import Mathlib

/-!
# Verification of the FILO2 solution kernel (`cobra::Solution`)

Shallow embedding of `src/solution/Solution.hpp`, `src/base/LRUCache.hpp`,
`src/base/FixedSizeValueStack.hpp` and the parts of `src/instance/Instance.hpp`
they use.

Modelling conventions:
* vertices are `Int` (the depot is `0`, `Solution::dummy_vertex` is `-1`);
  routes are `Nat` (`Solution::dummy_route` is `0`);
* `std::vector`s are total functions from the index;
* arc costs are `Int`: `Instance::get_cost` returns `fastround(..)`, an
  integer-valued `double`, so sums and differences of costs are exact;
* `assert`s are not executed by the model, they appear as hypotheses of the theorems;
* loops whose termination depends on the state take a fuel argument and return
  `none` when it runs out.
-/

namespace cobra

set_option linter.unusedTactic false
set_option linter.unreachableTactic false
set_option linter.unusedVariables false

/-- Pointwise overwrite of one slot of a vector, `v[a] = b`. -/
def upd {α : Type} {β : Type} [DecidableEq α] (f : α → β) (a : α) (b : β) : α → β :=
  fun x => if x = a then b else f x

/-! ## Instance -/

/-- The data of `cobra::Instance` read by the solution kernel: `get_vertices_num`,
`get_cost`, `get_demand`, `get_vehicle_capacity`. `get_depot()` is the constant `0`. -/
structure Instance where
  vertices_num : Nat
  cost : Int → Int → Int
  demand : Int → Int
  vehicle_capacity : Int

/-! ## LRUCache -/

/-- One node of the cache list, `LRUCache::Entry`. -/
structure Entry where
  prev : Int
  next : Int
  used : Bool

/-- The class `cobra::LRUCache`. -/
structure LRUCache where
  cache_size : Int
  cache : Int → Entry
  counter : Int
  head : Int
  tail : Int

namespace LRUCache

/-- Constructor `LRUCache(capacity_, vertices_num_)`. -/
def create (capacity_ : Int) : LRUCache :=
  { cache_size := capacity_, cache := fun _ => ⟨-1, -1, false⟩, counter := 0, head := -1, tail := -1 }

/-- The private method `LRUCache::remove`. -/
def remove (c : LRUCache) (vertex : Int) : LRUCache :=
  let prevEntry := (c.cache vertex).prev
  let nextEntry := (c.cache vertex).next
  let c1 : LRUCache :=
    if prevEntry = -1 then { c with head := nextEntry }
    else { c with cache := upd c.cache prevEntry { c.cache prevEntry with next := nextEntry } }
  let c2 : LRUCache :=
    if nextEntry = -1 then { c1 with tail := prevEntry }
    else { c1 with cache := upd c1.cache nextEntry { c1.cache nextEntry with prev := prevEntry } }
  { c2 with cache := upd c2.cache vertex ⟨-1, -1, false⟩ }

/-- The private method `LRUCache::splay_on_top`. -/
def splay_on_top (c : LRUCache) (vertex : Int) : LRUCache :=
  let c1 : LRUCache := { c with cache := upd c.cache vertex { c.cache vertex with used := true } }
  let c2 : LRUCache := { c1 with cache := upd c1.cache vertex { c1.cache vertex with next := c1.head } }
  let c3 : LRUCache :=
    if c2.head ≠ -1 then
      { c2 with cache := upd c2.cache c2.head { c2.cache c2.head with prev := vertex } }
    else c2
  let c4 : LRUCache := { c3 with head := vertex }
  let c5 : LRUCache := { c4 with cache := upd c4.cache vertex { c4.cache vertex with prev := -1 } }
  if c5.tail = -1 then { c5 with tail := c5.head } else c5

/-- The method `LRUCache::insert`. -/
def insert (c : LRUCache) (vertex : Int) : LRUCache :=
  if (c.cache vertex).used then
    (c.remove vertex).splay_on_top vertex
  else
    let c1 : LRUCache :=
      if c.counter = c.cache_size then c.remove c.tail
      else { c with counter := c.counter + 1 }
    c1.splay_on_top vertex

/-- The loop of `LRUCache::clear`, started at `curr`. -/
def clear_loop : Nat → LRUCache → Int → Option LRUCache
  | 0, _, _ => none
  | fuel + 1, c, curr =>
    if curr ≠ -1 then
      let next := (c.cache curr).next
      clear_loop fuel { c with cache := upd c.cache curr ⟨-1, -1, false⟩ } next
    else some c

/-- The method `LRUCache::clear`. -/
def clear (c : LRUCache) (fuel : Nat) : Option LRUCache :=
  match clear_loop fuel { c with counter := 0 } c.head with
  | some c1 => some { c1 with head := -1, tail := -1 }
  | none => none

/-- Membership in the set of recently modified vertices as a client sees it: `v` is met
when iterating `begin()`, `get_next(..)`, ... until `end()`; at most `fuel` entries are
visited, starting from `curr`. -/
def reaches (c : LRUCache) : Nat → Int → Int → Bool
  | 0, _, _ => false
  | fuel + 1, curr, v =>
    if curr = -1 then false
    else if curr = v then true
    else reaches c fuel (c.cache curr).next v

end LRUCache

/-! ## FixedSizeValueStack -/

/-- The class `FixedSizeValueStack<int>` (the route pool). -/
structure FixedSizeValueStack where
  array : Int → Nat
  begin : Int
  capacity : Int

namespace FixedSizeValueStack

/-- The method `get`: pops the top item. -/
def get (p : FixedSizeValueStack) : Nat × FixedSizeValueStack :=
  (p.array p.begin, { p with begin := p.begin + 1 })

/-- The method `push`. -/
def push (p : FixedSizeValueStack) (item : Nat) : FixedSizeValueStack :=
  { p with begin := p.begin - 1, array := upd p.array (p.begin - 1) item }

/-- The method `is_empty`. -/
def is_empty (p : FixedSizeValueStack) : Bool := decide (p.begin = p.capacity)

/-- The method `reset` with the initializer `index + 1` the solution passes. -/
def reset (p : FixedSizeValueStack) : FixedSizeValueStack :=
  { p with array := fun i => if 0 ≤ i ∧ i < p.capacity then (i + 1).toNat else p.array i, begin := 0 }

end FixedSizeValueStack

/-! ## Solution -/

/-- The struct `Solution::DepotNode`. -/
structure DepotNode where
  first_route : Nat
  num_routes : Int

/-- The struct `Solution::CustomerNode`. -/
structure CustomerNode where
  next : Int
  prev : Int
  route_ptr : Nat
  load_after : Int
  load_before : Int
  c_prev_curr : Int

/-- The struct `Solution::RouteNode`. -/
structure RouteNode where
  first_customer : Int
  last_customer : Int
  load : Int
  next : Nat
  prev : Nat
  size : Int
  needs_cumulative_load_update : Bool
  in_solution : Bool
  c_prev_curr : Int

/-- The enum `Solution::ActionType`. -/
inductive ActionType where
  | INSERT_VERTEX
  | REMOVE_VERTEX
  | CREATE_ROUTE
  | REMOVE_ROUTE
  | REVERSE_ROUTE_PATH
  | CREATE_ONE_CUSTOMER_ROUTE
  | REMOVE_ONE_CUSTOMER_ROUTE
  deriving DecidableEq

/-- The class `Solution::Action`. -/
structure Action where
  type : ActionType
  route : Nat
  i : Int
  j : Int
  deriving DecidableEq

namespace Action

/-- Method `Action::insert_vertex`. -/
def insert_vertex (route : Nat) (wh vertex : Int) : Action := ⟨.INSERT_VERTEX, route, vertex, wh⟩
/-- Method `Action::remove_vertex`. -/
def remove_vertex (route : Nat) (vertex : Int) : Action := ⟨.REMOVE_VERTEX, route, vertex, -1⟩
/-- Method `Action::create_route`. -/
def create_route (route : Nat) : Action := ⟨.CREATE_ROUTE, route, -1, -1⟩
/-- Method `Action::remove_route`. -/
def remove_route (route : Nat) : Action := ⟨.REMOVE_ROUTE, route, -1, -1⟩
/-- Method `Action::reverse_route_path`. -/
def reverse_route_path (route : Nat) (b e : Int) : Action := ⟨.REVERSE_ROUTE_PATH, route, b, e⟩
/-- Method `Action::create_one_customer_route`. -/
def create_one_customer_route (route : Nat) (customer : Int) : Action :=
  ⟨.CREATE_ONE_CUSTOMER_ROUTE, route, customer, -1⟩
/-- Method `Action::remove_one_customer_route`. -/
def remove_one_customer_route (route : Nat) (customer : Int) : Action :=
  ⟨.REMOVE_ONE_CUSTOMER_ROUTE, route, customer, -1⟩

end Action

/-- The data members of `cobra::Solution` (the instance reference is passed separately). -/
structure Solution where
  solution_cost : Int
  max_number_routes : Nat
  routes_pool : FixedSizeValueStack
  depot_node : DepotNode
  routes_list : Nat → RouteNode
  customers_list : Int → CustomerNode
  cache : LRUCache
  undo_list1 : List Action
  do_list1 : List Action
  do_list2 : List Action

namespace Solution

/-! ### Elementary assignments

Every statement of the mutating methods is one of the following assignments; the methods
below are their compositions, in the order of the source. -/

/-- Assignment `customers_list[x].next = v`. -/
def set_customer_next (s : Solution) (x : Int) (v : Int) : Solution :=
  { s with customers_list := upd s.customers_list x { s.customers_list x with next := v } }

/-- Assignment `customers_list[x].prev = v`. -/
def set_customer_prev (s : Solution) (x : Int) (v : Int) : Solution :=
  { s with customers_list := upd s.customers_list x { s.customers_list x with prev := v } }

/-- Assignment `customers_list[x].route_ptr = v`. -/
def set_customer_route_ptr (s : Solution) (x : Int) (v : Nat) : Solution :=
  { s with customers_list := upd s.customers_list x { s.customers_list x with route_ptr := v } }

/-- Assignment `customers_list[x].c_prev_curr = v`. -/
def set_customer_c_prev_curr (s : Solution) (x : Int) (v : Int) : Solution :=
  { s with customers_list := upd s.customers_list x { s.customers_list x with c_prev_curr := v } }

/-- Assignment `customers_list[x].load_before = v`. -/
def set_customer_load_before (s : Solution) (x : Int) (v : Int) : Solution :=
  { s with customers_list := upd s.customers_list x { s.customers_list x with load_before := v } }

/-- Assignment `customers_list[x].load_after = v`. -/
def set_customer_load_after (s : Solution) (x : Int) (v : Int) : Solution :=
  { s with customers_list := upd s.customers_list x { s.customers_list x with load_after := v } }

/-- Assignment `routes_list[r].first_customer = v`. -/
def set_route_first_customer (s : Solution) (r : Nat) (v : Int) : Solution :=
  { s with routes_list := upd s.routes_list r { s.routes_list r with first_customer := v } }

/-- Assignment `routes_list[r].last_customer = v`. -/
def set_route_last_customer (s : Solution) (r : Nat) (v : Int) : Solution :=
  { s with routes_list := upd s.routes_list r { s.routes_list r with last_customer := v } }

/-- Assignment `routes_list[r].load = v`. -/
def set_route_load (s : Solution) (r : Nat) (v : Int) : Solution :=
  { s with routes_list := upd s.routes_list r { s.routes_list r with load := v } }

/-- Assignment `routes_list[r].next = v`. -/
def set_route_next (s : Solution) (r : Nat) (v : Nat) : Solution :=
  { s with routes_list := upd s.routes_list r { s.routes_list r with next := v } }

/-- Assignment `routes_list[r].prev = v`. -/
def set_route_prev (s : Solution) (r : Nat) (v : Nat) : Solution :=
  { s with routes_list := upd s.routes_list r { s.routes_list r with prev := v } }

/-- Assignment `routes_list[r].size = v`. -/
def set_route_size (s : Solution) (r : Nat) (v : Int) : Solution :=
  { s with routes_list := upd s.routes_list r { s.routes_list r with size := v } }

/-- Assignment `routes_list[r].needs_cumulative_load_update = v`. -/
def set_route_needs_cumulative_load_update (s : Solution) (r : Nat) (v : Bool) : Solution :=
  { s with routes_list := upd s.routes_list r { s.routes_list r with needs_cumulative_load_update := v } }

/-- Assignment `routes_list[r].in_solution = v`. -/
def set_route_in_solution (s : Solution) (r : Nat) (v : Bool) : Solution :=
  { s with routes_list := upd s.routes_list r { s.routes_list r with in_solution := v } }

/-- Assignment `routes_list[r].c_prev_curr = v`. -/
def set_route_c_prev_curr (s : Solution) (r : Nat) (v : Int) : Solution :=
  { s with routes_list := upd s.routes_list r { s.routes_list r with c_prev_curr := v } }

/-- Statement `solution_cost += d`. -/
def add_cost (s : Solution) (d : Int) : Solution :=
  { s with solution_cost := s.solution_cost + d }

/-- Statement `cache.insert(v)`. -/
def cache_insert (s : Solution) (v : Int) : Solution :=
  { s with cache := s.cache.insert v }

/-- Statement `depot_node.first_route = r`. -/
def set_first_route (s : Solution) (r : Nat) : Solution :=
  { s with depot_node := { s.depot_node with first_route := r } }

/-- Statement `depot_node.num_routes += d`. -/
def add_num_routes (s : Solution) (d : Int) : Solution :=
  { s with depot_node := { s.depot_node with num_routes := s.depot_node.num_routes + d } }

/-- Statement `routes_pool.get()` (the returned item is `routes_pool.get.1` of the state before). -/
def pool_get (s : Solution) : Solution :=
  { s with routes_pool := s.routes_pool.get.2 }

/-- Statement `routes_pool.push(r)`. -/
def pool_push (s : Solution) (r : Nat) : Solution :=
  { s with routes_pool := s.routes_pool.push r }

/-- The block `if constexpr (record_action) { do_list1.emplace_back(d); undo_list1.emplace_back(u); }`. -/
def record (s : Solution) (record_action : Bool) (d u : Action) : Solution :=
  if record_action then
    { s with do_list1 := s.do_list1 ++ [d], undo_list1 := s.undo_list1 ++ [u] }
  else s

/-- State left by the constructor `Solution(instance_, history_len)`: the vectors are
value-initialised, the pool is filled with `1 .. vertices_num`. The source leaves
`solution_cost` at `INFINITY` until `reset()` sets it to 0; the model has 0 from the start. -/
def construct (I : Instance) (history_len : Int) : Solution :=
  { solution_cost := 0
    max_number_routes := I.vertices_num + 1
    routes_pool :=
      FixedSizeValueStack.reset { array := fun _ => 0, begin := 0, capacity := (I.vertices_num : Int) }
    depot_node := ⟨0, 0⟩
    routes_list := fun _ => ⟨0, 0, 0, 0, 0, 0, false, false, 0⟩
    customers_list := fun _ => ⟨0, 0, 0, 0, 0, 0⟩
    cache := LRUCache.create history_len
    undo_list1 := []
    do_list1 := []
    do_list2 := [] }

/-- Method `reset_route`. -/
def reset_route (s : Solution) (route : Nat) : Solution :=
  (((((((s.set_route_load route 0).set_route_size route 0).set_route_first_customer route (-1)
    ).set_route_last_customer route (-1)).set_route_prev route 0).set_route_next route 0
    ).set_route_needs_cumulative_load_update route true).set_route_in_solution route false

/-- Method `reset_vertex`. -/
def reset_vertex (s : Solution) (customer : Int) : Solution :=
  ((s.set_customer_next customer (-1)).set_customer_prev customer (-1)).set_customer_route_ptr customer 0

/-- The loop `for r in 0 .. max_number_routes: reset_route(r)` of `reset`. -/
def reset_routes (s : Solution) : Nat → Solution
  | 0 => s
  | n + 1 => (reset_routes s n).reset_route n

/-- The loop `for i in 0 .. vertices_num: reset_vertex(i)` of `reset`. -/
def reset_vertices (s : Solution) : Nat → Solution
  | 0 => s
  | n + 1 => (reset_vertices s n).reset_vertex (n : Int)

/-- The first statements of `reset`: `solution_cost = 0`, `routes_pool.reset()`,
`depot_node.first_route = dummy_route`, `depot_node.num_routes = 0`. -/
def reset_scalars (s : Solution) : Solution :=
  { s with solution_cost := 0, routes_pool := s.routes_pool.reset, depot_node := ⟨0, 0⟩ }

/-- The two loops of `reset` after its first statements. -/
def reset_lists (I : Instance) (s : Solution) : Solution :=
  (s.reset_scalars.reset_routes s.reset_scalars.max_number_routes).reset_vertices I.vertices_num

/-- The last statements of `reset`, after `cache.clear()` has left the cache `c`: the
action lists are cleared. -/
def reset_finish (s : Solution) (c : LRUCache) : Solution :=
  { s with cache := c, undo_list1 := [], do_list1 := [], do_list2 := [] }

/-- Method `reset`. -/
def reset (I : Instance) (s : Solution) (fuel : Nat) : Option Solution :=
  match (reset_lists I s).cache.clear fuel with
  | some c => some ((reset_lists I s).reset_finish c)
  | none => none

/-- A freshly constructed solution after `reset()`, the state every run starts from; the
fall-back value is never used, see `reset_construct`. -/
def fresh (I : Instance) (history_len : Int) : Solution :=
  (reset I (construct I history_len) 1).getD (construct I history_len)

/-- Method `get_cost`. -/
def get_cost (s : Solution) : Int := s.solution_cost

/-- Method `get_routes_num`. -/
def get_routes_num (s : Solution) : Int := s.depot_node.num_routes

/-- Method `is_route_in_solution`. -/
def is_route_in_solution (s : Solution) (route : Nat) : Bool := (s.routes_list route).in_solution

/-- Method `is_customer_in_solution`. -/
def is_customer_in_solution (s : Solution) (customer : Int) : Bool :=
  decide ((s.customers_list customer).route_ptr ≠ 0)

/-- Method `contains_vertex`. -/
def contains_vertex (s : Solution) (route : Nat) (vertex : Int) : Bool :=
  decide ((s.customers_list vertex).route_ptr = route ∨ vertex = 0)

/-- Method `is_route_empty`. -/
def is_route_empty (s : Solution) (route : Nat) : Bool := decide ((s.routes_list route).load = 0)

/-- Method `is_missing_depot`. -/
def is_missing_depot (s : Solution) (route : Nat) : Bool :=
  decide ((s.routes_list route).first_customer = -1)

/-- Method `get_route_load`. -/
def get_route_load (s : Solution) (route : Nat) : Int := (s.routes_list route).load

/-- Method `get_route_size`. -/
def get_route_size (s : Solution) (route : Nat) : Int := (s.routes_list route).size

/-- Method `get_first_customer`. -/
def get_first_customer (s : Solution) (route : Nat) : Int := (s.routes_list route).first_customer

/-- Method `get_last_customer`. -/
def get_last_customer (s : Solution) (route : Nat) : Int := (s.routes_list route).last_customer

/-- Method `get_next_vertex(route, vertex)`. -/
def get_next_vertex (s : Solution) (route : Nat) (vertex : Int) : Int :=
  if vertex = 0 then (s.routes_list route).first_customer else (s.customers_list vertex).next

/-- Method `get_prev_vertex(route, vertex)`. -/
def get_prev_vertex (s : Solution) (route : Nat) (vertex : Int) : Int :=
  if vertex = 0 then (s.routes_list route).last_customer else (s.customers_list vertex).prev

/-- Method `get_cost_prev_vertex(route, vertex)`. -/
def get_cost_prev_vertex (s : Solution) (route : Nat) (vertex : Int) : Int :=
  if vertex = 0 then (s.routes_list route).c_prev_curr else (s.customers_list vertex).c_prev_curr

/-- Method `get_svc_begin`. -/
def get_svc_begin (s : Solution) : Int := s.cache.head

/-- Method `get_svc_next`. -/
def get_svc_next (s : Solution) (i : Int) : Int := (s.cache.cache i).next

/-- Method `get_svc_end`. -/
def get_svc_end (_s : Solution) : Int := -1

/-- Method `set_next_vertex_ptr`. -/
def set_next_vertex_ptr (s : Solution) (route : Nat) (vertex next : Int) : Solution :=
  if vertex = 0 then s.set_route_first_customer route next else s.set_customer_next vertex next

/-- Method `set_prev_vertex_ptr`. -/
def set_prev_vertex_ptr (s : Solution) (route : Nat) (vertex prev : Int) : Solution :=
  if vertex = 0 then s.set_route_last_customer route prev else s.set_customer_prev vertex prev

/-- Assignment to the cached cost of the arc entering `vertex`: the pattern
`if (x == depot) routes_list[route].c_prev_curr = c; else customers_list[x].c_prev_curr = c;`
that the mutating methods spell out inline. -/
def set_cost_prev_vertex (s : Solution) (route : Nat) (vertex c : Int) : Solution :=
  if vertex = 0 then s.set_route_c_prev_curr route c else s.set_customer_c_prev_curr vertex c

/-- Method `request_route`; returns the route index and the new state. -/
def request_route (s : Solution) : Nat × Solution :=
  let route := s.routes_pool.get.1
  (route, ((s.pool_get).set_route_in_solution route true).add_num_routes 1)

/-- Method `release_route`. -/
def release_route (s : Solution) (route : Nat) : Solution :=
  let prevRoute := (s.routes_list route).prev
  let nextRoute := (s.routes_list route).next
  let s3 := ((s.set_route_next prevRoute nextRoute).set_route_prev nextRoute prevRoute).add_num_routes (-1)
  let s4 := if s3.depot_node.first_route = route then s3.set_first_route nextRoute else s3
  (s4.reset_route route).pool_push route

/-- Method `build_one_customer_route<record_action>(customer)`; returns the route index and
the new state. -/
def build_one_customer_route (I : Instance) (s : Solution) (record_action : Bool) (customer : Int) :
    Nat × Solution :=
  let route := s.request_route.1
  let s2 := s.request_route.2.record record_action
    (Action.create_one_customer_route route customer) (Action.remove_one_customer_route route customer)
  let s3 := (((s2.set_customer_prev customer 0).set_customer_next customer 0
    ).set_customer_route_ptr customer route).set_customer_c_prev_curr customer (I.cost 0 customer)
  let next_route := s3.depot_node.first_route
  let s7 := (((s3.set_route_next route next_route).set_first_route route).set_route_prev route 0
    ).set_route_prev next_route route
  let s8 := (((s7.set_route_first_customer route customer).set_route_last_customer route customer
    ).set_route_load route (I.demand customer)).set_route_size route 1
  let s9 := s8.set_route_c_prev_curr route (s8.customers_list customer).c_prev_curr
  let s10 := s9.add_cost (2 * (s9.customers_list customer).c_prev_curr)
  (route, (s10.cache_insert customer).set_route_needs_cumulative_load_update route true)

/-- Method `remove_vertex<record_action>(route, vertex)`; returns the new state and `delta`. -/
def remove_vertex (I : Instance) (s : Solution) (record_action : Bool) (route : Nat) (vertex : Int) :
    Solution × Int :=
  let s0 := s.record record_action (Action.remove_vertex route vertex)
    (Action.insert_vertex route (s.get_next_vertex route vertex) vertex)
  if vertex = 0 then
    let next := (s0.routes_list route).first_customer
    let prev := (s0.routes_list route).last_customer
    let s1 := ((s0.cache_insert vertex).cache_insert prev).cache_insert next
    let s3 := (s1.set_prev_vertex_ptr route next prev).set_next_vertex_ptr route prev next
    let s4 := (s3.set_route_first_customer route (-1)).set_route_last_customer route (-1)
    let s5 := s4.set_customer_c_prev_curr next (I.cost prev next)
    let delta := (s5.customers_list next).c_prev_curr - I.cost prev vertex - I.cost vertex next
    ((s5.add_cost delta).set_route_needs_cumulative_load_update route true, delta)
  else
    let next := (s0.customers_list vertex).next
    let prev := (s0.customers_list vertex).prev
    let s1 := ((s0.cache_insert vertex).cache_insert prev).cache_insert next
    let s2 :=
      if vertex = (s1.routes_list route).first_customer then
        (s1.set_route_first_customer route next).set_prev_vertex_ptr route next 0
      else if vertex = (s1.routes_list route).last_customer then
        (s1.set_route_last_customer route prev).set_next_vertex_ptr route prev 0
      else
        (s1.set_customer_next prev next).set_customer_prev next prev
    let s3 := s2.set_route_load route ((s2.routes_list route).load - I.demand vertex)
    let s4 := s3.set_route_size route ((s3.routes_list route).size - 1)
    let c_prev_next := I.cost prev next
    let s5 := s4.set_cost_prev_vertex route next c_prev_next
    let delta := c_prev_next - I.cost prev vertex - I.cost vertex next
    (((s5.add_cost delta).reset_vertex vertex).set_route_needs_cumulative_load_update route true, delta)

/-- Method `remove_route<record_action>(route)`. -/
def remove_route (s : Solution) (record_action : Bool) (route : Nat) : Solution :=
  (s.record record_action (Action.remove_route route) (Action.create_route route)).release_route route

/-- Method `insert_vertex_before<record_action>(route, where, vertex)`. -/
def insert_vertex_before (I : Instance) (s : Solution) (record_action : Bool) (route : Nat)
    (wh vertex : Int) : Solution :=
  let s0 := s.record record_action (Action.insert_vertex route wh vertex)
    (Action.remove_vertex route vertex)
  let s9 :=
    if vertex = 0 then
      let prev := (s0.customers_list wh).prev
      let s1 := (s0.cache_insert prev).cache_insert wh
      let s2 := (s1.set_route_first_customer route wh).set_route_last_customer route prev
      let s4 := (s2.set_customer_next prev 0).set_customer_prev wh 0
      let s5 := s4.set_route_c_prev_curr route (I.cost prev 0)
      let old_cost_prev_where := (s5.customers_list wh).c_prev_curr
      let s6 := s5.set_customer_c_prev_curr wh (I.cost 0 wh)
      let delta := (s6.routes_list route).c_prev_curr + (s6.customers_list wh).c_prev_curr
                     - old_cost_prev_where
      s6.add_cost delta
    else
      let prev := s0.get_prev_vertex route wh
      let s1 := (s0.cache_insert prev).cache_insert wh
      let s2 := ((s1.set_customer_next vertex wh).set_customer_prev vertex prev
        ).set_customer_route_ptr vertex route
      let s4 := (s2.set_next_vertex_ptr route prev vertex).set_prev_vertex_ptr route wh vertex
      let c_vertex_where := I.cost vertex wh
      let old_cost_prev_where := s4.get_cost_prev_vertex route wh
      let s5 := s4.set_cost_prev_vertex route wh c_vertex_where
      let s6 := s5.set_customer_c_prev_curr vertex (I.cost prev vertex)
      let delta := (s6.customers_list vertex).c_prev_curr + c_vertex_where - old_cost_prev_where
      let s7 := s6.add_cost delta
      let s8 := s7.set_route_load route ((s7.routes_list route).load + I.demand vertex)
      s8.set_route_size route ((s8.routes_list route).size + 1)
  s9.set_route_needs_cumulative_load_update route true

/-- One pass through the body of the `do .. while (curr != stop)` loop of
`reverse_route_path`; returns the new state and the next `curr`. -/
def reverse_step (s : Solution) (route : Nat) (curr : Int) : Solution × Int :=
  let s1 := s.cache_insert curr
  let prev := s1.get_prev_vertex route curr
  let next := s1.get_next_vertex route curr
  let s2 :=
    if curr = 0 then
      ((s1.set_route_last_customer route next).set_route_first_customer route prev
        ).set_route_c_prev_curr route (s1.customers_list next).c_prev_curr
    else
      ((s1.set_customer_prev curr next).set_customer_next curr prev
        ).set_customer_c_prev_curr curr (s1.get_cost_prev_vertex route next)
  (s2, next)

/-- The `do .. while (curr != stop)` loop of `reverse_route_path`. -/
def reverse_loop (route : Nat) (stop : Int) : Nat → Solution → Int → Option Solution
  | 0, _, _ => none
  | fuel + 1, s, curr =>
    let r := s.reverse_step route curr
    if r.2 ≠ stop then reverse_loop route stop fuel r.1 r.2 else some r.1

/-- Method `reverse_route_path<record_action>(route, vertex_begin, vertex_end)`. -/
def reverse_route_path (I : Instance) (s : Solution) (record_action : Bool) (route : Nat)
    (vertex_begin vertex_end : Int) (fuel : Nat) : Option Solution :=
  let s0 := s.record record_action (Action.reverse_route_path route vertex_begin vertex_end)
    (Action.reverse_route_path route vertex_end vertex_begin)
  let pre := s0.get_prev_vertex route vertex_begin
  let stop := s0.get_next_vertex route vertex_end
  let c_pre_begin := s0.get_cost_prev_vertex route vertex_begin
  let c_pre_vertex_end := I.cost pre vertex_end
  let c_vertex_begin_stop := I.cost stop vertex_begin
  let s1 := (s0.cache_insert pre).cache_insert stop
  match reverse_loop route stop fuel s1 vertex_begin with
  | none => none
  | some s2 =>
    let s3 :=
      if vertex_end = pre ∧ vertex_begin = stop then
        s2.set_cost_prev_vertex route vertex_end c_pre_begin
      else
        (((((s2.set_next_vertex_ptr route vertex_begin stop).set_next_vertex_ptr route pre vertex_end
          ).set_prev_vertex_ptr route vertex_end pre).set_cost_prev_vertex route vertex_end
            c_pre_vertex_end).set_prev_vertex_ptr route stop vertex_begin).set_cost_prev_vertex
              route stop c_vertex_begin_stop
    let delta := - I.cost pre vertex_begin - I.cost vertex_end stop + c_pre_vertex_end
                   + c_vertex_begin_stop
    some ((s3.add_cost delta).set_route_needs_cumulative_load_update route true)

/-- The loop of `append_route` that re-labels the appended customers. -/
def append_loop (route : Nat) : Nat → Solution → Int → Option Solution
  | 0, _, _ => none
  | fuel + 1, s, curr =>
    if curr ≠ 0 then
      let s2 := (s.set_customer_route_ptr curr route).cache_insert curr
      append_loop route fuel s2 (s2.customers_list curr).next
    else some s

/-- Method `append_route(route, route_to_append)`. -/
def append_route (I : Instance) (s : Solution) (route route_to_append : Nat) (fuel : Nat) :
    Option Solution :=
  let route_end := (s.routes_list route).last_customer
  let route_to_append_start := (s.routes_list route_to_append).first_customer
  let s2 := ((s.set_customer_next route_end route_to_append_start
    ).set_customer_prev route_to_append_start route_end
    ).set_customer_c_prev_curr route_to_append_start (I.cost route_end route_to_append_start)
  let s3 := s2.set_route_last_customer route (s2.routes_list route_to_append).last_customer
  let s4 := s3.set_route_load route ((s3.routes_list route).load + (s3.routes_list route_to_append).load)
  let s5 := s4.set_route_size route ((s4.routes_list route).size + (s4.routes_list route_to_append).size)
  let s6 := s5.set_route_c_prev_curr route (s5.routes_list route_to_append).c_prev_curr
  let delta := (s6.customers_list route_to_append_start).c_prev_curr - I.cost route_end 0
                 - I.cost 0 route_to_append_start
  let s7 := (s6.add_cost delta).cache_insert route_end
  match append_loop route fuel s7 route_to_append_start with
  | none => none
  | some s8 =>
    some ((s8.release_route route_to_append).set_route_needs_cumulative_load_update route true)

/-- The walk `for (curr = start; curr != depot; curr = next(curr))` used by `to_string`,
`store_to_file` and `is_feasible`: the customers met from `curr` up to the depot. -/
def walk (s : Solution) : Nat → Int → Option (List Int)
  | 0, _ => none
  | fuel + 1, curr =>
    if curr = 0 then some []
    else (walk s fuel (s.customers_list curr).next).map (fun l => curr :: l)

/-- The customers of `route` in visiting order, walking from `first_customer` to the depot. -/
def route_customers (s : Solution) (route : Nat) (fuel : Nat) : Option (List Int) :=
  s.walk fuel (s.routes_list route).first_customer

/-- The loop of `get_route_cost`, started at `curr` with partial sum `sum`. -/
def route_cost_loop (I : Instance) (s : Solution) : Nat → Int → Int → Option Int
  | 0, _, _ => none
  | fuel + 1, curr, sum =>
    if curr ≠ 0 then
      let next := (s.customers_list curr).next
      route_cost_loop I s fuel next (sum + I.cost curr next)
    else some sum

/-- Method `get_route_cost`. -/
def get_route_cost (I : Instance) (s : Solution) (route : Nat) (fuel : Nat) : Option Int :=
  let curr := (s.routes_list route).first_customer
  route_cost_loop I s fuel curr (I.cost 0 curr)

/-- Method `apply_action` (release build: the `CREATE_ROUTE` case only holds assertions). -/
def apply_action (I : Instance) (s : Solution) (a : Action) (fuel : Nat) : Option Solution :=
  match a.type with
  | .INSERT_VERTEX =>
    if s.is_route_in_solution a.route then some (insert_vertex_before I s false a.route a.j a.i)
    else some (build_one_customer_route I s false a.i).2
  | .REMOVE_VERTEX => some (remove_vertex I s false a.route a.i).1
  | .CREATE_ROUTE => some s
  | .REMOVE_ROUTE => some (s.remove_route false a.route)
  | .REVERSE_ROUTE_PATH => reverse_route_path I s false a.route a.i a.j fuel
  | .CREATE_ONE_CUSTOMER_ROUTE => some (build_one_customer_route I s false a.i).2
  | .REMOVE_ONE_CUSTOMER_ROUTE =>
    some ((remove_vertex I s false a.route a.i).1.remove_route false a.route)

/-- Applies a list of actions front to back. -/
def apply_actions (I : Instance) (fuel : Nat) : List Action → Solution → Option Solution
  | [], s => some s
  | a :: rest, s =>
    match apply_action I s a fuel with
    | some s1 => apply_actions I fuel rest s1
    | none => none

/-- Method `this->apply_do_list1(solution)`. -/
def apply_do_list1 (I : Instance) (this solution : Solution) (fuel : Nat) : Option Solution :=
  apply_actions I fuel this.do_list1 solution

/-- Method `this->apply_undo_list1(solution)`: the undo list is walked from its last entry
to its first. -/
def apply_undo_list1 (I : Instance) (this solution : Solution) (fuel : Nat) : Option Solution :=
  apply_actions I fuel this.undo_list1.reverse solution

/-- Method `clear_do_list1`. -/
def clear_do_list1 (s : Solution) : Solution := { s with do_list1 := [] }

/-- Method `clear_undo_list1`. -/
def clear_undo_list1 (s : Solution) : Solution := { s with undo_list1 := [] }

end Solution

/-! ## Specification-level definitions

A route is described by the cyclic list of its vertices: the depot (when the route has
it) and its customers, in visiting order, up to rotation. -/

/-- The links along the path `x, l`: each vertex is followed by the next one, preceded by
the previous one, and caches the cost of the arc entering it. -/
def Seg (cost : Int → Int → Int) (nx pv cc : Int → Int) : Int → List Int → Prop
  | _, [] => True
  | x, y :: rest => nx x = y ∧ pv y = x ∧ cc y = cost x y ∧ Seg cost nx pv cc y rest

/-- The list `l` read cyclically is linked by `nx`, `pv`, with cached arc costs `cc`. -/
def IsCycle (cost : Int → Int → Int) (nx pv cc : Int → Int) : List Int → Prop
  | [] => False
  | x :: t => Seg cost nx pv cc x (t ++ [x])

/-- Sum of the arc costs along the path `x, l`. -/
def segCost (cost : Int → Int → Int) : Int → List Int → Int
  | _, [] => 0
  | x, y :: rest => cost x y + segCost cost y rest

/-- Sum of the arc costs of the cycle `l`, the closing arc included. -/
def cycCost (cost : Int → Int → Int) : List Int → Int
  | [] => 0
  | x :: t => segCost cost x (t ++ [x])

/-- Last vertex of the path `x, l`. -/
def lastFrom : Int → List Int → Int
  | x, [] => x
  | _, y :: rest => lastFrom y rest

/-- The path `x, l` without its last vertex. -/
def initFrom : Int → List Int → List Int
  | _, [] => []
  | x, y :: rest => x :: initFrom y rest

/-- The customers of a cyclic vertex list (the depot is dropped). -/
def custs (l : List Int) : List Int := l.filter (fun v => decide (v ≠ 0))

/-- Sum of the demands of the customers of `l`. -/
def loadOf (I : Instance) (l : List Int) : Int := ((custs l).map I.demand).sum

/-- Number of customers of `l`. -/
def sizeOf (l : List Int) : Int := ((custs l).length : Int)

/-- Two customer nodes agree on the fields the representation reads. -/
def CustomerNode.agree (a b : CustomerNode) : Prop :=
  a.next = b.next ∧ a.prev = b.prev ∧ a.route_ptr = b.route_ptr ∧ a.c_prev_curr = b.c_prev_curr

/-- Two route nodes agree on the fields the representation reads (the links of the list of
routes and the lazy-update flag are left out). -/
def RouteNode.agree (a b : RouteNode) : Prop :=
  a.first_customer = b.first_customer ∧ a.last_customer = b.last_customer ∧ a.load = b.load ∧
    a.size = b.size ∧ a.in_solution = b.in_solution ∧ a.c_prev_curr = b.c_prev_curr

/-- Route `r` of solution `s` is described by the cyclic vertex list `l` (`[]` when the
route is not in the solution). -/
structure RouteRep (I : Instance) (s : Solution) (r : Nat) (l : List Int) : Prop where
  present_iff : l ≠ [] ↔ (s.routes_list r).in_solution = true
  cycle : l ≠ [] →
    IsCycle I.cost (s.get_next_vertex r) (s.get_prev_vertex r) (s.get_cost_prev_vertex r) l
  nodup : l.Nodup
  range : ∀ v ∈ l, 0 ≤ v ∧ v < (I.vertices_num : Int)
  mem_iff : ∀ v, v ≠ 0 → (v ∈ l ↔ ((s.customers_list v).route_ptr = r ∧ r ≠ 0))
  load : l ≠ [] → (s.routes_list r).load = loadOf I l
  size : l ≠ [] → (s.routes_list r).size = sizeOf l
  missing : l ≠ [] → 0 ∉ l →
    (s.routes_list r).first_customer = -1 ∧ (s.routes_list r).last_customer = -1

/-- Solution `s` is described by the family `A` of cyclic vertex lists, one per route
index: the structural part of the representation invariant (links, cached arc costs,
route pointers, loads, sizes, route pool). -/
structure Rep (I : Instance) (s : Solution) (A : Nat → List Int) : Prop where
  routes : ∀ r, RouteRep I s r (A r)
  bound : ∀ r, A r ≠ [] → 0 < r ∧ r < s.max_number_routes
  unserved : ∀ v, 0 < v → v < (I.vertices_num : Int) → (s.customers_list v).route_ptr = 0 →
    (s.customers_list v).next = -1 ∧ (s.customers_list v).prev = -1
  pool_le : s.routes_pool.begin ≤ s.routes_pool.capacity
  pool_absent : ∀ i, s.routes_pool.begin ≤ i → i < s.routes_pool.capacity →
    A (s.routes_pool.array i) = [] ∧ 0 < s.routes_pool.array i ∧
      s.routes_pool.array i < s.max_number_routes
  pool_inj : ∀ i j, s.routes_pool.begin ≤ i → i < s.routes_pool.capacity →
    s.routes_pool.begin ≤ j → j < s.routes_pool.capacity →
    s.routes_pool.array i = s.routes_pool.array j → i = j
  pool_nonneg : 0 ≤ s.routes_pool.begin
  pool_cap : s.routes_pool.capacity = (s.max_number_routes : Int) - 1

/-- The stored total cost is the sum, over the routes, of the arc costs of their cycles. -/
def CostOK (I : Instance) (s : Solution) (A : Nat → List Int) : Prop :=
  s.solution_cost = ∑ r in Finset.range s.max_number_routes, cycCost I.cost (A r)

/-- The cost function is symmetric and vanishes on the diagonal. -/
def CostSym (I : Instance) : Prop :=
  (∀ i j, I.cost i j = I.cost j i) ∧ ∀ i, I.cost i i = 0

/-- What `remove_vertex` needs to know about the position of `v`: a customer is the first
(last) one exactly when its predecessor (successor) is the depot, and a route that loses its
depot has customers. -/
def Solution.RemovePre (s : Solution) (r : Nat) (v : Int) : Prop :=
  (v ≠ 0 → (v = (s.routes_list r).first_customer ↔ (s.customers_list v).prev = 0) ∧
    (v = (s.routes_list r).last_customer ↔ (s.customers_list v).next = 0)) ∧
  (v = 0 → (s.routes_list r).first_customer ≠ 0 ∧ (s.routes_list r).last_customer ≠ 0)

/-- What `insert_vertex_before` needs to know: the inserted vertex is neither `wh` nor its
predecessor, and a depot is inserted between two customers. -/
def Solution.InsertPre (s : Solution) (r : Nat) (wh v : Int) : Prop :=
  wh ≠ v ∧ s.get_prev_vertex r wh ≠ v ∧ (v = 0 → wh ≠ 0 ∧ s.get_prev_vertex r wh ≠ 0)

/-- Following `nx` from `x` runs through `l` and then reaches `stop`. -/
def NextChain (nx : Int → Int) : Int → List Int → Int → Prop
  | x, [], stop => nx x = stop
  | x, y :: rest, stop => nx x = y ∧ NextChain nx y rest stop

/-- State `s2` is state `s` after the loop of `reverse_route_path` has passed over the
vertices `xs` of route `r`: their links are swapped, nothing else has changed (the cached
cost of the last vertex visited is left unspecified). -/
structure Reversed (s s2 : Solution) (r : Nat) (xs : List Int) (last : Int) : Prop where
  nx : ∀ u, s2.get_next_vertex r u =
    if u ∈ xs then s.get_prev_vertex r u else s.get_next_vertex r u
  pv : ∀ u, s2.get_prev_vertex r u =
    if u ∈ xs then s.get_next_vertex r u else s.get_prev_vertex r u
  cc : ∀ u, u ≠ last → s2.get_cost_prev_vertex r u =
    if u ∈ xs then s.get_cost_prev_vertex r (s.get_next_vertex r u)
    else s.get_cost_prev_vertex r u
  custs : ∀ u, u ∉ xs → s2.customers_list u = s.customers_list u
  route_ptr : ∀ u, (s2.customers_list u).route_ptr = (s.customers_list u).route_ptr
  routes : ∀ r2, r2 ≠ r → s2.routes_list r2 = s.routes_list r2
  load : (s2.routes_list r).load = (s.routes_list r).load
  size : (s2.routes_list r).size = (s.routes_list r).size
  in_solution : (s2.routes_list r).in_solution = (s.routes_list r).in_solution
  cost : s2.solution_cost = s.solution_cost
  pool : s2.routes_pool = s.routes_pool
  maxr : s2.max_number_routes = s.max_number_routes
  depot : s2.depot_node = s.depot_node

/-- The statements of `reverse_route_path` after its loop, in the general case, applied to
the state `s2` the loop has left; `pre`, `stop` are the vertices read before the loop. -/
def Solution.reverse_finish (I : Instance) (s2 : Solution) (r : Nat) (a b pre stop : Int) :
    Solution :=
  (((((((s2.set_next_vertex_ptr r a stop).set_next_vertex_ptr r pre b).set_prev_vertex_ptr r b pre
    ).set_cost_prev_vertex r b (I.cost pre b)).set_prev_vertex_ptr r stop a
    ).set_cost_prev_vertex r stop (I.cost stop a)).add_cost
      (- I.cost pre a - I.cost b stop + I.cost pre b + I.cost stop a)
    ).set_route_needs_cumulative_load_update r true

/-- The statements of `reverse_route_path` after its loop when `vertex_begin` and
`vertex_end` are contiguous (the whole cycle was reversed). -/
def Solution.reverse_finish_whole (I : Instance) (s2 : Solution) (r : Nat) (a b : Int)
    (c_pre_begin : Int) : Solution :=
  ((s2.set_cost_prev_vertex r b c_pre_begin).add_cost
      (- I.cost b a - I.cost b a + I.cost b b + I.cost a a)
    ).set_route_needs_cumulative_load_update r true


/-- Vertex `v` is linked in route `r`: the route is in the solution and either `v` is a
customer served by it or `v` is the depot and the route is not missing it. -/
def Solution.linked (s : Solution) (r : Nat) (v : Int) : Prop :=
  (s.routes_list r).in_solution = true ∧
    (if v = 0 then (s.routes_list r).first_customer ≠ -1 else (s.customers_list v).route_ptr = r)

/-- Solution `t` has the routes of solution `s`: every customer has the same predecessor,
successor and route, the same routes are present under the same identifiers, with the same
first and last customer, load and size. -/
structure SameRoutes (I : Instance) (s t : Solution) : Prop where
  next : ∀ u, 0 < u → u < (I.vertices_num : Int) →
    (t.customers_list u).next = (s.customers_list u).next
  prev : ∀ u, 0 < u → u < (I.vertices_num : Int) →
    (t.customers_list u).prev = (s.customers_list u).prev
  route_ptr : ∀ u, 0 < u → u < (I.vertices_num : Int) →
    (t.customers_list u).route_ptr = (s.customers_list u).route_ptr
  in_solution : ∀ r, (t.routes_list r).in_solution = (s.routes_list r).in_solution
  first : ∀ r, (s.routes_list r).in_solution = true →
    (t.routes_list r).first_customer = (s.routes_list r).first_customer
  last : ∀ r, (s.routes_list r).in_solution = true →
    (t.routes_list r).last_customer = (s.routes_list r).last_customer
  load : ∀ r, (s.routes_list r).in_solution = true →
    (t.routes_list r).load = (s.routes_list r).load
  size : ∀ r, (s.routes_list r).in_solution = true →
    (t.routes_list r).size = (s.routes_list r).size

/-- Every linked vertex has mutually inverse links:
`get_prev_vertex(r, get_next_vertex(r, v)) = v` and `get_next_vertex(r, get_prev_vertex(r, v)) = v`. -/
def Solution.LinksOK (s : Solution) : Prop :=
  ∀ r v, s.linked r v →
    s.get_prev_vertex r (s.get_next_vertex r v) = v ∧
    s.get_next_vertex r (s.get_prev_vertex r v) = v

/-- Every linked vertex caches the cost of the arc entering it:
`c_prev_curr = cost(prev(v), v)`. -/
def Solution.CachedOK (I : Instance) (s : Solution) : Prop :=
  ∀ r v, s.linked r v → s.get_cost_prev_vertex r v = I.cost (s.get_prev_vertex r v) v

/-- For every present route that has its depot, the walk from `first_customer` to the depot
returns, and the stored load and size are the sum of the demands and the number of the
customers it meets. -/
def Solution.LoadOK (I : Instance) (s : Solution) : Prop :=
  ∀ r, (s.routes_list r).in_solution = true → (s.routes_list r).first_customer ≠ -1 →
    ∃ l, s.route_customers r (I.vertices_num + 1) = some l ∧
      (s.routes_list r).load = (l.map I.demand).sum ∧
      (s.routes_list r).size = (l.length : Int)

/-- The cycles `A` give the arc costs of the routes as `get_route_cost` computes them: for
every present route that has its depot the loop of `get_route_cost` returns, with the arc
cost of the cycle of the route (both depot arcs included). -/
def Solution.RouteCostsOK (I : Instance) (s : Solution) (A : Nat → List Int) : Prop :=
  ∀ r, (s.routes_list r).in_solution = true → (s.routes_list r).first_customer ≠ -1 →
    Solution.get_route_cost I s r (I.vertices_num + 1) = some (cycCost I.cost (A r))

/-! ### A small instance

The depot and three customers on a line, at abscissas 0, 1, 2, 3; the cost of an arc is the
squared distance of its ends, every customer has demand 2. -/

/-- The instance. -/
def lineInstance : Instance :=
  ⟨4, fun i j => (i - j) * (i - j), fun v => if v = 0 then 0 else 2, 10⟩

/-- The empty solution of `lineInstance`, with a cache of five entries. -/
def lineEmpty : Solution := Solution.fresh lineInstance 5

/-- The solution with the single route `1: depot, 1, depot`. -/
def lineOne : Solution := (Solution.build_one_customer_route lineInstance lineEmpty false 1).2

/-- The solution with the single route `1: depot, 1, 2, depot`. -/
def lineTwo : Solution := Solution.insert_vertex_before lineInstance lineOne false 1 0 2

/-- The cyclic list describing route 1 of `lineOne`. -/
def lineOneA : Nat → List Int := upd (fun _ => []) 1 [0, 1]

/-- The cyclic list describing route 1 of `lineTwo`. -/
def lineTwoA : Nat → List Int := upd lineOneA 1 [2, 0, 1]

/-- The solution with the two routes `1: depot, 1, depot` and `2: depot, 2, depot`. -/
def lineBoth : Solution := (Solution.build_one_customer_route lineInstance lineOne false 2).2

/-- The cyclic lists describing the routes of `lineBoth`. -/
def lineBothA : Nat → List Int := upd lineOneA 2 [0, 2]

/-- The statements of `append_route` before its loop, see `append_route_eq`. -/
def Solution.append_link (I : Instance) (s : Solution) (route route_to_append : Nat) : Solution :=
  let route_end := (s.routes_list route).last_customer
  let route_to_append_start := (s.routes_list route_to_append).first_customer
  let s2 := ((s.set_customer_next route_end route_to_append_start
    ).set_customer_prev route_to_append_start route_end
    ).set_customer_c_prev_curr route_to_append_start (I.cost route_end route_to_append_start)
  let s3 := s2.set_route_last_customer route (s2.routes_list route_to_append).last_customer
  let s4 := s3.set_route_load route ((s3.routes_list route).load + (s3.routes_list route_to_append).load)
  let s5 := s4.set_route_size route ((s4.routes_list route).size + (s4.routes_list route_to_append).size)
  let s6 := s5.set_route_c_prev_curr route (s5.routes_list route_to_append).c_prev_curr
  let delta := (s6.customers_list route_to_append_start).c_prev_curr - I.cost route_end 0
                 - I.cost 0 route_to_append_start
  (s6.add_cost delta).cache_insert route_end

/-! ### Recorded trajectories -/

/-- Two route pools hold the same items: same `begin`, same capacity, and the same item at
every index from `begin` on (the slots below `begin` are not read before being written). -/
def PoolEq (p q : FixedSizeValueStack) : Prop :=
  p.begin = q.begin ∧ p.capacity = q.capacity ∧
    ∀ i, p.begin ≤ i → i < p.capacity → p.array i = q.array i

/-- The solutions reached from `s0` by recorded mutations (`record_action = true`), each
called within its preconditions. The index is `some r` between a `remove_vertex` that has
emptied route `r` and the `remove_route(r)` that follows it; in between only `remove_vertex`,
`insert_vertex_before` and `reverse_route_path` on other routes are performed.
`reverse_route_path` is not applied to a whole cycle. -/
inductive Traj (I : Instance) (fuel : Nat) (s0 : Solution) : Option Nat → Solution → Prop
  | start : Traj I fuel s0 none s0
  | build {s : Solution} (c : Int) : Traj I fuel s0 none s →
      0 < c → c < (I.vertices_num : Int) → (s.customers_list c).route_ptr = 0 →
      s.routes_pool.begin < s.routes_pool.capacity →
      Traj I fuel s0 none (Solution.build_one_customer_route I s true c).2
  | remove {p : Option Nat} {s : Solution} (r : Nat) (v : Int) : Traj I fuel s0 p s →
      s.linked r v → s.get_next_vertex r v ≠ v → p ≠ some r →
      Traj I fuel s0 p (Solution.remove_vertex I s true r v).1
  | insert {p : Option Nat} {s : Solution} (r : Nat) (w v : Int) : Traj I fuel s0 p s →
      s.linked r w →
      ((v = 0 ∧ (s.routes_list r).first_customer = -1) ∨
        (0 < v ∧ v < (I.vertices_num : Int) ∧ (s.customers_list v).route_ptr = 0)) →
      p ≠ some r →
      Traj I fuel s0 p (Solution.insert_vertex_before I s true r w v)
  | reverse {p : Option Nat} {s s2 : Solution} (r : Nat) (a b : Int) : Traj I fuel s0 p s →
      s.linked r a → s.linked r b → a ≠ b → s.get_prev_vertex r a ≠ b →
      Solution.reverse_route_path I s true r a b fuel = some s2 → p ≠ some r →
      Traj I fuel s0 p s2
  | empty {s : Solution} (r : Nat) (c : Int) : Traj I fuel s0 none s →
      c ≠ 0 → s.linked r c → (s.customers_list c).next = 0 → (s.customers_list c).prev = 0 →
      Traj I fuel s0 (some r) (Solution.remove_vertex I s true r c).1
  | remove_route {s : Solution} (r : Nat) : Traj I fuel s0 (some r) s →
      Traj I fuel s0 none (s.remove_route true r)

/-- Relation kept while the undo list is replayed, between the description `A` of the
recorded state and the description `B` of the state being rewound: the same cycles, except
that a route emptied and then removed (`p = some r`) is still absent from the rewound state,
on top of its pool. -/
def Rel (p : Option Nat) (A B : Nat → List Int) (ps pt : FixedSizeValueStack) : Prop :=
  match p with
  | none => (∀ q, A q ~r B q) ∧ PoolEq pt ps
  | some r => A r = [0] ∧ B r = [] ∧ (∀ q, q ≠ r → A q ~r B q) ∧ PoolEq pt (ps.push r)

/-- The solution reached from `lineBoth` by the recorded calls `remove_vertex(2, 2)`,
`build_one_customer_route(3)` (which returns route 3), `remove_vertex(3, 3)`,
`insert_vertex_before(3, depot, 2)` and `remove_route(2)`: the routes `1: depot, 1, depot`
and `3: depot, 2, depot`. -/
def lineLate : Solution :=
  (Solution.insert_vertex_before lineInstance
    (Solution.remove_vertex lineInstance
      (Solution.build_one_customer_route lineInstance
        (Solution.remove_vertex lineInstance lineBoth true 2 2).1 true 3).2 true 3 3).1
    true 3 0 2).remove_route true 2

/-- The solution reached from `lineBoth` by emptying route 1 and removing it, recorded. -/
def lineRemoved : Solution :=
  (Solution.remove_vertex lineInstance lineBoth true 1 1).1.remove_route true 1

/-- The recorded state `s`, described by `A`, can be rewound: it is represented, its stored
cost is the sum of the arc costs, and replaying its undo list on any state related to it by
`Rel` returns a state described by the cycles `A0` of the initial solution. -/
def Rewinds (I : Instance) (fuel : Nat) (s0 : Solution) (A0 : Nat → List Int) (p : Option Nat)
    (s : Solution) (A : Nat → List Int) : Prop :=
  Rep I s A ∧ CostOK I s A ∧ (∀ r, p = some r → A r = [0]) ∧
    ∀ t B, Rep I t B → CostOK I t B → t.max_number_routes = s.max_number_routes →
      Rel p A B s.routes_pool t.routes_pool →
      ∃ t0 B0, Solution.apply_actions I fuel s.undo_list1.reverse t = some t0 ∧
        Rep I t0 B0 ∧ CostOK I t0 B0 ∧ (∀ q, A0 q ~r B0 q) ∧
        t0.max_number_routes = s0.max_number_routes ∧ PoolEq t0.routes_pool s0.routes_pool

/-- The recorded state `s`, described by `A`, can be replayed: it is represented, its
stored cost is the sum of the arc costs, and applying its do list to any state described by
the cycles `A0` of the initial solution, with the same pool, returns a state described by
`A`, with the pool of `s`. -/
def Replays (I : Instance) (fuel : Nat) (s0 : Solution) (A0 : Nat → List Int)
    (s : Solution) (A : Nat → List Int) : Prop :=
  Rep I s A ∧ CostOK I s A ∧
    ∀ t0 B0, Rep I t0 B0 → CostOK I t0 B0 → t0.max_number_routes = s0.max_number_routes →
      (∀ q, A0 q ~r B0 q) → PoolEq t0.routes_pool s0.routes_pool →
      ∃ t B, Solution.apply_actions I fuel s.do_list1 t0 = some t ∧
        Rep I t B ∧ CostOK I t B ∧ (∀ q, A q ~r B q) ∧
        t.max_number_routes = s.max_number_routes ∧ PoolEq t.routes_pool s.routes_pool

/-- The solution reached from `lineBoth` by the recorded calls `remove_vertex(2, 2)`,
`insert_vertex_before(1, depot, 2)` and `remove_route(2)`: customer 2 is moved to the end of
route 1 and the emptied route 2 is removed. -/
def lineMoved : Solution :=
  (Solution.insert_vertex_before lineInstance
    (Solution.remove_vertex lineInstance lineBoth true 2 2).1 true 1 0 2).remove_route true 2

/-- The solution reached from `lineMoved` by the recorded call
`reverse_route_path(1, 1, 2)`: route 1 becomes `depot, 2, 1, depot`. -/
def lineTurned : Solution :=
  (Solution.reverse_route_path lineInstance lineMoved true 1 1 2 4).getD lineMoved

/-- The solution reached from `lineTurned` by the recorded call
`build_one_customer_route(3)`. -/
def lineChain : Solution := (Solution.build_one_customer_route lineInstance lineTurned true 3).2

/-! ## The cache as a list -/

/-- Method `LRUCache::size`. -/
def LRUCache.size (c : LRUCache) : Int := c.counter

/-- The client loop `for (i = begin(); i != end(); i = get_next(i))` over the cache, started
at `curr`: the list of the entries visited, in the order of the visit. -/
def LRUCache.iterate (c : LRUCache) : Nat → Int → Option (List Int)
  | 0, _ => none
  | fuel + 1, curr =>
    if curr ≠ -1 then (LRUCache.iterate c fuel (c.cache curr).next).map (fun l => curr :: l)
    else some []

/-- The entries of `l` form a doubly linked chain in `cache`: each one is used, the `prev` of
each one is the entry before it (`p` for the first one) and the `next` of each one is the
entry after it (`-1` for the last one). -/
def LChain (cache : Int → Entry) : Int → List Int → Prop
  | _, [] => True
  | p, x :: rest =>
    (cache x).prev = p ∧ (cache x).used = true ∧ (cache x).next = rest.headD (-1) ∧
      LChain cache x rest

/-- The links of the cache `c` describe the list `l`: `l` has no duplicates and does not
contain `dummy_vertex`, its entries are chained from `head` to `tail`, and no other entry is
used. -/
structure LRUCache.Links (c : LRUCache) (l : List Int) : Prop where
  nodup : l.Nodup
  valid : ∀ v ∈ l, v ≠ -1
  chain : LChain c.cache (-1) l
  head_eq : c.head = l.headD (-1)
  tail_eq : c.tail = l.getLastD (-1)
  unused : ∀ v, v ∉ l → (c.cache v).used = false

/-- The cache `c` holds the list `l`: its links describe `l`, its counter is the length of
`l`, and `l` is not longer than the capacity. -/
structure LRUCache.Holds (c : LRUCache) (l : List Int) : Prop where
  links : c.Links l
  counter_eq : c.counter = l.length
  length_le : (l.length : Int) ≤ c.cache_size

/-- A call of the cache interface: `insert(v)` or `clear()`. -/
inductive LruCall where
  | insert (v : Int)
  | clear
  deriving DecidableEq, Repr

/-- The list after `insert(v)`, as the specification words it: an absent `v` is put at the
front and, if the list already held `H` elements, the last one is dropped; a present `v` is
moved to the front, the others keep their relative order. -/
def lruInsert (H : Nat) (v : Int) (l : List Int) : List Int :=
  if v ∈ l then v :: l.filter (fun x => decide (x ≠ v))
  else if l.length = H then v :: l.dropLast
  else v :: l

/-- The list after one call, as the specification words it: `clear()` empties the list. -/
def lruStep (H : Nat) (l : List Int) : LruCall → List Int
  | LruCall.insert v => lruInsert H v l
  | LruCall.clear => []

/-- The list after a sequence of calls, as the specification words it. -/
def lruList (H : Nat) (l : List Int) (calls : List LruCall) : List Int :=
  calls.foldl (lruStep H) l

/-- One call on the cache of the source; `clear()` runs its loop with the given fuel. -/
def LRUCache.call (fuel : Nat) (c : LRUCache) : LruCall → Option LRUCache
  | LruCall.insert v => some (c.insert v)
  | LruCall.clear => c.clear fuel

/-- A sequence of calls on the cache of the source. -/
def LRUCache.calls (fuel : Nat) : LRUCache → List LruCall → Option LRUCache
  | c, [] => some c
  | c, a :: rest => (LRUCache.call fuel c a).bind (fun c1 => LRUCache.calls fuel c1 rest)

/-! ## The list of routes -/

/-- Method `get_first_route`. -/
def Solution.get_first_route (s : Solution) : Nat := s.depot_node.first_route

/-- Method `get_next_route`. -/
def Solution.get_next_route (s : Solution) (route : Nat) : Nat := (s.routes_list route).next

/-- Method `get_end_route`. -/
def Solution.get_end_route (_s : Solution) : Nat := 0

/-- The client loop `for (r = get_first_route(); r != get_end_route(); r = get_next_route(r))`
started at `curr`: the list of the routes visited, in the order of the visit. -/
def Solution.routes_from (s : Solution) : Nat → Nat → Option (List Nat)
  | 0, _ => none
  | fuel + 1, curr =>
    if curr ≠ s.get_end_route then
      (Solution.routes_from s fuel (s.get_next_route curr)).map (fun l => curr :: l)
    else some []

/-- The routes of `L` form a doubly linked chain in `rl`: the `prev` of each one is the route
before it (`p` for the first one) and the `next` of each one is the route after it
(`dummy_route` for the last one). -/
def RChain (rl : Nat → RouteNode) : Nat → List Nat → Prop
  | _, [] => True
  | p, r :: rest => (rl r).prev = p ∧ (rl r).next = rest.headD 0 ∧ RChain rl r rest

/-- The linked list of routes of the solution is `L`: `L` has no duplicates and does not
contain `dummy_route`, and its routes are chained from `depot_node.first_route` on. -/
structure Solution.RouteList (s : Solution) (L : List Nat) : Prop where
  nodup : L.Nodup
  valid : ∀ r ∈ L, r ≠ 0
  chain : RChain s.routes_list 0 L
  first_eq : s.depot_node.first_route = L.headD 0

/-- An instance on a line like `lineInstance`, in which the customers have demand 0. -/
def zeroInstance : Instance :=
  ⟨4, fun i j => (i - j) * (i - j), fun _ => 0, 10⟩

/-- The solution of `zeroInstance` with the single route `1: depot, 1, depot`. -/
def zeroOne : Solution :=
  (Solution.build_one_customer_route zeroInstance (Solution.fresh zeroInstance 5) false 1).2

/-! ## Cumulative loads -/

namespace Solution

/-- The `while (curr != depot)` loop of `update_cumulative_route_loads`. -/
def cumulative_loop (I : Instance) : Nat → Solution → Int → Int → Option Solution
  | 0, _, _, _ => none
  | fuel + 1, s, prev, curr =>
    if curr ≠ 0 then
      let s1 := s.set_customer_load_before curr
        ((s.customers_list prev).load_before + I.demand curr)
      let s2 := s1.set_customer_load_after curr
        ((s1.customers_list prev).load_after - I.demand prev)
      cumulative_loop I fuel s2 curr (s2.customers_list curr).next
    else some s

/-- Method `update_cumulative_route_loads`. -/
def update_cumulative_route_loads (I : Instance) (s : Solution) (route : Nat) (fuel : Nat) :
    Option Solution :=
  let prev := (s.routes_list route).first_customer
  let s1 := s.set_customer_load_before prev (I.demand prev)
  let s2 := s1.set_customer_load_after prev (s1.routes_list route).load
  cumulative_loop I fuel s2 prev (s2.customers_list prev).next

/-- The statements `get_route_load_before_included` and `get_route_load_after_included`
begin with: the cumulative loads of the route of `customer` are updated if the route is
flagged, and the flag is cleared. -/
def refresh_cumulative_loads (I : Instance) (s : Solution) (customer : Int) (fuel : Nat) :
    Option Solution :=
  let route := (s.customers_list customer).route_ptr
  if (s.routes_list route).needs_cumulative_load_update = true then
    (s.update_cumulative_route_loads I route fuel).map
      (fun s1 => s1.set_route_needs_cumulative_load_update route false)
  else some s

/-- Method `get_route_load_before_included`; returns the value and the new state. -/
def get_route_load_before_included (I : Instance) (s : Solution) (customer : Int)
    (fuel : Nat) : Option (Int × Solution) :=
  (s.refresh_cumulative_loads I customer fuel).map
    (fun s1 => ((s1.customers_list customer).load_before, s1))

/-- Method `get_route_load_after_included`; returns the value and the new state. -/
def get_route_load_after_included (I : Instance) (s : Solution) (customer : Int)
    (fuel : Nat) : Option (Int × Solution) :=
  (s.refresh_cumulative_loads I customer fuel).map
    (fun s1 => ((s1.customers_list customer).load_after, s1))

end Solution

/-- The stored cumulative loads of the customers `t` of a route are up to date, `before`
being the load of the customers that precede `t` in the route and `after` the load of `t`:
for each customer `load_before` is the load up to and including it and `load_after` is the
load from it on. -/
def CumFresh (I : Instance) (cl : Int → CustomerNode) : Int → Int → List Int → Prop
  | _, _, [] => True
  | before, after, c :: rest =>
    (cl c).load_before = before + I.demand c ∧ (cl c).load_after = after ∧
      CumFresh I cl (before + I.demand c) (after - I.demand c) rest

/-- No route that has its depot has its flag `needs_cumulative_load_update` cleared while
the stored cumulative loads of its customers are stale. -/
def CumOK (I : Instance) (s : Solution) (A : Nat → List Int) : Prop :=
  ∀ r t, A r ~r (0 :: t) → (s.routes_list r).needs_cumulative_load_update = false →
    CumFresh I s.customers_list 0 ((t.map I.demand).sum) t

/-- The solutions reached from the freshly reset solution by sequences of mutations, each
called within its preconditions, together with the cycles that describe them (a cycle may be
replaced by a rotation of it). `flag` is the assignment `needs_cumulative_load_update = true`
that ends `swap_tails` and `split`, which are otherwise sequences of `remove_vertex` and
`insert_vertex_before`. -/
inductive Mutated (I : Instance) (fuel : Nat) : Solution → (Nat → List Int) → Prop
  | fresh (h : Int) : Mutated I fuel (Solution.fresh I h) (fun _ => [])
  | rotate {s : Solution} {A : Nat → List Int} (r : Nat) (l : List Int) :
      Mutated I fuel s A → A r ~r l → Mutated I fuel s (upd A r l)
  | build {s : Solution} {A : Nat → List Int} (ra : Bool) (c : Int) : Mutated I fuel s A →
      0 < c → c < (I.vertices_num : Int) → (s.customers_list c).route_ptr = 0 →
      s.routes_pool.begin < s.routes_pool.capacity →
      Mutated I fuel (Solution.build_one_customer_route I s ra c).2
        (upd A (Solution.build_one_customer_route I s ra c).1 [0, c])
  | remove {s : Solution} {A : Nat → List Int} (ra : Bool) (r : Nat) (v : Int) (t : List Int) :
      Mutated I fuel s A → A r = v :: t → t ≠ [] →
      Mutated I fuel (Solution.remove_vertex I s ra r v).1 (upd A r t)
  | insert {s : Solution} {A : Nat → List Int} (ra : Bool) (r : Nat) (w v : Int)
      (t : List Int) : Mutated I fuel s A → A r = w :: t → v ∉ A r →
      (v ≠ 0 → (s.customers_list v).route_ptr = 0) → 0 ≤ v → v < (I.vertices_num : Int) →
      Mutated I fuel (Solution.insert_vertex_before I s ra r w v) (upd A r (v :: w :: t))
  | remove_route {s : Solution} {A : Nat → List Int} (ra : Bool) (r : Nat) :
      Mutated I fuel s A → A r = [0] → Mutated I fuel (s.remove_route ra r) (upd A r [])
  | reverse {s s2 : Solution} {A : Nat → List Int} (ra : Bool) (r : Nat) (a b : Int)
      (xs ys : List Int) : Mutated I fuel s A → A r = a :: (xs ++ ys) → xs ≠ [] →
      lastFrom a xs = b → Solution.reverse_route_path I s ra r a b fuel = some s2 →
      Mutated I fuel s2 (upd A r ((a :: xs).reverse ++ ys))
  | append {s s2 : Solution} {A : Nat → List Int} (R S : Nat) (LR LS : List Int) :
      Mutated I fuel s A → R ≠ S → A R = 0 :: LR → A S = 0 :: LS → LR ≠ [] → LS ≠ [] →
      Solution.append_route I s R S fuel = some s2 →
      Mutated I fuel s2 (upd (upd A S []) R (0 :: (LR ++ LS)))
  | flag {s : Solution} {A : Nat → List Int} (r : Nat) : Mutated I fuel s A →
      Mutated I fuel (s.set_route_needs_cumulative_load_update r true) A
  | load_before {s s2 : Solution} {A : Nat → List Int} (r : Nat) (c x : Int) :
      Mutated I fuel s A → (0 : Int) ∈ A r → c ∈ A r → c ≠ 0 →
      Solution.get_route_load_before_included I s c fuel = some (x, s2) →
      Mutated I fuel s2 A
  | load_after {s s2 : Solution} {A : Nat → List Int} (r : Nat) (c x : Int) :
      Mutated I fuel s A → (0 : Int) ∈ A r → c ∈ A r → c ≠ 0 →
      Solution.get_route_load_after_included I s c fuel = some (x, s2) →
      Mutated I fuel s2 A
/-- State `s2` has the stored cumulative loads of `s`, the flags of the routes of `rs` are
set and the flags of the other routes are those of `s`. -/
def CumFrame (s s2 : Solution) (rs : List Nat) : Prop :=
  (∀ u, (s2.customers_list u).load_before = (s.customers_list u).load_before ∧
    (s2.customers_list u).load_after = (s.customers_list u).load_after) ∧
  (∀ q, q ∉ rs → (s2.routes_list q).needs_cumulative_load_update =
    (s.routes_list q).needs_cumulative_load_update) ∧
  (∀ q ∈ rs, (s2.routes_list q).needs_cumulative_load_update = true)

/-! ## BinaryHeap and MoveGeneratorsHeap

Shallow embedding of `src/base/BinaryHeap.hpp`, instantiated as in
`src/movegen/MoveGenerators.hpp` (`MoveGeneratorsHeap`): the elements are pointers to move
generators, here the indices of the generators; the fields `delta` and `heap_index` of the
generators are kept in the same state. The vector `heap` is a function from the position
together with its size. As for the arc costs, `delta` is an exact number (`Int`): the
stored deltas are sums and differences of integer-valued arc costs. -/

/-- The heap of move generators together with the fields of the generators it reads and
writes. -/
structure MGHeap where
  heap : Nat → Nat
  size : Nat
  delta : Nat → Int
  heap_index : Nat → Int

namespace MGHeap

/-- Macro `LEFT`. -/
def LEFT (x : Nat) : Nat := 2 * x + 1

/-- Macro `RIGHT`. -/
def RIGHT (x : Nat) : Nat := 2 * x + 2

/-- Macro `PARENT`, used for positions other than 0 only. -/
def PARENT (x : Nat) : Nat := (x - 1) / 2

/-- The heap before any call: no element, every generator has `heap_index = -1` (the
default member initializer of `MoveGenerator`). -/
def empty (delta : Nat → Int) : MGHeap :=
  { heap := fun _ => 0, size := 0, delta := delta, heap_index := fun _ => -1 }

/-- Functor `MGCompare`. -/
def cmp (st : MGHeap) (mg1 mg2 : Nat) : Int := st.delta mg1 - st.delta mg2

/-- Functor `MGSetIdx`. -/
def set_idx (st : MGHeap) (mg : Nat) (idx : Int) : MGHeap :=
  { heap := st.heap, size := st.size, delta := st.delta,
    heap_index := upd st.heap_index mg idx }

/-- Assignment `heap[k] = mg`. -/
def set_heap (st : MGHeap) (k : Nat) (mg : Nat) : MGHeap :=
  { heap := upd st.heap k mg, size := st.size, delta := st.delta,
    heap_index := st.heap_index }

/-- Statement `heap.pop_back()`. -/
def pop_back (st : MGHeap) : MGHeap :=
  { heap := st.heap, size := st.size - 1, delta := st.delta, heap_index := st.heap_index }

/-- Statement `heap.emplace_back(mg)`. -/
def emplace_back (st : MGHeap) (mg : Nat) : MGHeap :=
  { heap := upd st.heap st.size mg, size := st.size + 1, delta := st.delta,
    heap_index := st.heap_index }

/-- Statement `heap.clear()`. -/
def clear (st : MGHeap) : MGHeap :=
  { heap := st.heap, size := 0, delta := st.delta, heap_index := st.heap_index }

/-- Method `MoveGenerator::set_delta` of generator `mg`. -/
def set_delta (st : MGHeap) (mg : Nat) (value : Int) : MGHeap :=
  { heap := st.heap, size := st.size, delta := upd st.delta mg value,
    heap_index := st.heap_index }

/-- Method `min_lr`; `none` stands for `unheaped`. -/
def min_lr (st : MGHeap) (parent : Nat) (lindex rindex : Nat) : Option Nat :=
  let hsize := st.size
  let smallest :=
    if rindex < hsize ∧ st.cmp (st.heap rindex) (st.heap lindex) < 0 then rindex else lindex
  if smallest < hsize ∧ st.cmp (st.heap smallest) parent < 0 then some smallest else none

/-- The `while (smallest != unheaped)` loop of `heapify`; returns the state and the final
`hindex`. -/
def heapify_loop : Nat → MGHeap → Nat → Nat → Option Nat → Option (MGHeap × Nat)
  | 0, _, _, _, _ => none
  | _ + 1, st, _, hindex, none => some (st, hindex)
  | fuel + 1, st, elem, hindex, some smallest =>
    let st1 := st.set_idx (st.heap smallest) hindex
    let st2 := st1.set_heap hindex (st1.heap smallest)
    heapify_loop fuel st2 elem smallest (st2.min_lr elem (LEFT smallest) (RIGHT smallest))

/-- Method `heapify`. The loop is given `size + 1` passes, which is enough, see
`heapify_ok`. -/
def heapify (st : MGHeap) (hindex : Nat) : Option MGHeap :=
  match st.min_lr (st.heap hindex) (LEFT hindex) (RIGHT hindex) with
  | none => some st
  | some smallest =>
    let elem := st.heap hindex
    match heapify_loop (st.size + 1) st elem hindex (some smallest) with
    | some (st1, h) => some ((st1.set_idx elem h).set_heap h elem)
    | none => none

/-- The loop of `upsift`; returns the state and the final `hindex`. At each test of the
loop condition `pindex` equals `hindex`, so that `pindex = PARENT(pindex)` is the parent of
`hindex`. -/
def upsift_loop : Nat → MGHeap → Nat → Nat → Option (MGHeap × Nat)
  | 0, _, _, _ => none
  | fuel + 1, st, elem, hindex =>
    if hindex ≠ 0 ∧ st.cmp elem (st.heap (PARENT hindex)) < 0 then
      let pindex := PARENT hindex
      let st1 := st.set_idx (st.heap pindex) hindex
      let st2 := st1.set_heap hindex (st1.heap pindex)
      upsift_loop fuel st2 elem pindex
    else some (st, hindex)

/-- Method `upsift`. The loop is given `hindex + 1` passes, which is enough, see
`upsift_ok`. -/
def upsift (st : MGHeap) (hindex : Nat) : Option MGHeap :=
  if hindex = 0 then some st
  else
    let elem := st.heap hindex
    match upsift_loop (hindex + 1) st elem hindex with
    | some (st1, h) => some ((st1.set_idx elem h).set_heap h elem)
    | none => none

/-- The loop `for (auto& t : heap) SetIdx()(t, unheaped)` of `reset`, over the first `k`
positions. -/
def reset_loop (st : MGHeap) : Nat → MGHeap
  | 0 => st
  | k + 1 => (reset_loop st k).set_idx (st.heap k) (-1)

/-- Method `reset`. -/
def reset (st : MGHeap) : MGHeap := (st.reset_loop st.size).clear

/-- Method `insert`. -/
def insert (st : MGHeap) (elem : Nat) : Option MGHeap :=
  let hindex := st.size
  let st1 := st.set_idx elem hindex
  let st2 := st1.emplace_back elem
  st2.upsift hindex

/-- Method `get`; returns the head and the new state. -/
def get (st : MGHeap) : Option (Nat × MGHeap) :=
  let st1 := st.set_idx (st.heap 0) (-1)
  let elem := st1.heap 0
  if st1.size = 1 then some (elem, st1.pop_back)
  else
    let st2 := st1.set_idx (st1.heap (st1.size - 1)) 0
    let st3 := (st2.set_heap 0 (st2.heap (st2.size - 1))).pop_back
    (st3.heapify 0).map (fun st4 => (elem, st4))

/-- Method `replace`. -/
def replace (st : MGHeap) (hindex : Nat) (elem : Nat) : Option MGHeap :=
  let case3 := st.cmp (st.heap hindex) elem
  let st1 := st.set_idx (st.heap hindex) (-1)
  let st2 := st1.set_idx elem hindex
  let st3 := st2.set_heap hindex elem
  if case3 > 0 then st3.upsift hindex
  else if case3 < 0 then st3.heapify hindex
  else some st3

/-- Method `remove`. -/
def remove (st : MGHeap) (hindex : Nat) : Option MGHeap :=
  if (hindex : Int) < (st.size : Int) - 1 then
    let last := st.heap (st.size - 1)
    st.pop_back.replace hindex last
  else
    some (st.set_idx (st.heap hindex) (-1)).pop_back

/-- Functor `MGUpdate`; returns the new state and the difference `old - new`. -/
def updt (st : MGHeap) (mg : Nat) (delta : Int) : MGHeap × Int :=
  (st.set_delta mg delta, st.delta mg - delta)

/-- Method `update`, called by `MoveGeneratorsHeap::change_value`. -/
def update (st : MGHeap) (hindex : Nat) (value : Int) : Option MGHeap :=
  let r := st.updt (st.heap hindex) value
  if r.2 > 0 then r.1.upsift hindex
  else if r.2 < 0 then r.1.heapify hindex
  else some r.1

/-- Method `MoveGeneratorsHeap::change_value`. -/
def change_value (st : MGHeap) (heap_index : Nat) (value : Int) : Option MGHeap :=
  st.update heap_index value

/-- The check `is_heap` of the source, as a proposition: the element at position `n` carries
heap index `n`, and no child has a smaller delta than its parent. -/
def is_heap (st : MGHeap) : Prop :=
  (∀ n, n < st.size → st.heap_index (st.heap n) = n) ∧
  (∀ n, n < st.size →
    (LEFT n < st.size → ¬ st.cmp (st.heap (LEFT n)) (st.heap n) < 0) ∧
    (RIGHT n < st.size → ¬ st.cmp (st.heap (RIGHT n)) (st.heap n) < 0))

end MGHeap

/-- The heap order on the keys of `n` positions: no position has a smaller key than its
parent. -/
def HeapOrd (key : Nat → Int) (n : Nat) : Prop :=
  ∀ k, 0 < k → k < n → key (MGHeap.PARENT k) ≤ key k

/-- The heap order but at position `h`, whose key may be smaller than that of its parent;
the children of `h` are not below the parent of `h`. -/
def UpOrd (key : Nat → Int) (n h : Nat) : Prop :=
  (∀ k, 0 < k → k < n → k ≠ h → key (MGHeap.PARENT k) ≤ key k) ∧
  (∀ c, 0 < c → c < n → MGHeap.PARENT c = h → 0 < h → key (MGHeap.PARENT h) ≤ key c)

/-- The heap order but below position `h`, whose key may be larger than those of its
children; the children of `h` are not below the parent of `h`. -/
def DownOrd (key : Nat → Int) (n h : Nat) : Prop :=
  (∀ k, 0 < k → k < n → MGHeap.PARENT k ≠ h → key (MGHeap.PARENT k) ≤ key k) ∧
  (∀ c, 0 < c → c < n → MGHeap.PARENT c = h → 0 < h → key (MGHeap.PARENT h) ≤ key c)

/-- The positions `0 .. n - 1` of `arr` hold distinct generators, each of which, but the one
at position `h`, carries its position as heap index; the generators not in `arr` carry -1. -/
def HoleIdx (arr : Nat → Nat) (n : Nat) (hidx : Nat → Int) (h : Nat) : Prop :=
  (∀ a b, a < n → b < n → arr a = arr b → a = b) ∧
  (∀ k, k < n → k ≠ h → hidx (arr k) = k) ∧
  (∀ m, (∀ k, k < n → arr k ≠ m) → hidx m = -1)

/-- The generators in the heap are distinct, the generator at position `n` carries heap
index `n`, and every generator that is not in the heap carries heap index -1. -/
structure MGHeap.Linked (st : MGHeap) : Prop where
  inj : ∀ a b, a < st.size → b < st.size → st.heap a = st.heap b → a = b
  idx : ∀ n, n < st.size → st.heap_index (st.heap n) = n
  out : ∀ m, (∀ k, k < st.size → st.heap k ≠ m) → st.heap_index m = -1

/-- The invariant of the heap: the generators in the heap are distinct, the generator at
position `n` carries heap index `n`, every generator that is not in the heap carries heap
index -1, and no child has a smaller delta than its parent. -/
structure MGHeap.OK (st : MGHeap) : Prop where
  linked : st.Linked
  ord : HeapOrd (fun k => st.delta (st.heap k)) st.size

/-- A call of the interface of `MoveGeneratorsHeap`. -/
inductive HeapCall where
  | reset
  | insert (mg : Nat)
  | get
  | remove (heap_index : Nat)
  | change_value (heap_index : Nat) (value : Int)
  deriving DecidableEq, Repr

/-- The call is valid in state `st`: `insert` is given a generator that is not in the heap,
`get` is called on a heap that is not empty, the heap index given to `remove` or
`change_value` is a position of the heap. -/
def HeapCall.valid (st : MGHeap) : HeapCall → Prop
  | HeapCall.reset => True
  | HeapCall.insert mg => st.heap_index mg = -1
  | HeapCall.get => 0 < st.size
  | HeapCall.remove i => i < st.size
  | HeapCall.change_value i _ => i < st.size

/-- The state after the call. -/
def MGHeap.call (st : MGHeap) : HeapCall → Option MGHeap
  | HeapCall.reset => some st.reset
  | HeapCall.insert mg => st.insert mg
  | HeapCall.get => st.get.map (fun r => r.2)
  | HeapCall.remove i => st.remove i
  | HeapCall.change_value i v => st.change_value i v

/-- The states reached from the empty heap by valid calls; between the calls the client may
assign the delta of a generator that is not in the heap (`MoveGenerator::set_delta`). -/
inductive HeapReach (delta : Nat → Int) : MGHeap → Prop
  | init : HeapReach delta (MGHeap.empty delta)
  | step {st st2 : MGHeap} (c : HeapCall) : HeapReach delta st → c.valid st →
      st.call c = some st2 → HeapReach delta st2
  | set_delta {st : MGHeap} (mg : Nat) (value : Int) : HeapReach delta st →
      st.heap_index mg = -1 → HeapReach delta (st.set_delta mg value)

instance (st : MGHeap) (c : HeapCall) : Decidable (c.valid st) := by
  cases c <;> unfold HeapCall.valid <;> infer_instance

/-- Deltas of the generators of the small heap: generator `m` has delta `10 - m`. -/
def heapDelta : Nat → Int := fun m => 10 - (m : Int)

/-- The calls that build the small heap `heapDemo`. -/
def heapCalls : List HeapCall :=
  [HeapCall.insert 1, HeapCall.insert 2, HeapCall.insert 3, HeapCall.insert 4,
    HeapCall.change_value 0 20, HeapCall.remove 1, HeapCall.get, HeapCall.insert 5]

/-- The state after a list of calls, `none` if one of them is not valid. -/
def MGHeap.calls : MGHeap → List HeapCall → Option MGHeap
  | st, [] => some st
  | st, c :: rest =>
    if c.valid st then (st.call c).bind (fun st2 => MGHeap.calls st2 rest) else none

/-- The small heap reached from the empty heap by `heapCalls`. -/
def heapDemo : MGHeap :=
  ((MGHeap.empty heapDelta).calls heapCalls).getD (MGHeap.empty heapDelta)

/-! ## SparseIntSet and MoveGenerators

Shallow embedding of `src/base/SparseIntSet.hpp` and of the class `MoveGenerators` of
`src/movegen/MoveGenerators.hpp`. The neighbour lists `Instance::get_neighbors_of` are a
parameter `nb`. A move generator is the pair of its vertices; the vector `moves` is a list.
The edge costs are the integer-valued arc costs, so that the test
`fabs(cij - cjn) < 0.00001` is the test `cij = cjn`. -/

/-- The class `cobra::SparseIntSet`. -/
structure SparseIntSet where
  flags : Int → Bool
  elements : List Int

namespace SparseIntSet

/-- Constructor `SparseIntSet(entries_num)`. -/
def create : SparseIntSet := { flags := fun _ => false, elements := [] }

/-- Method `contains`. -/
def contains (s : SparseIntSet) (value : Int) : Bool := s.flags value

/-- Method `insert_without_checking_existance`. -/
def insert_without_checking_existance (s : SparseIntSet) (value : Int) : SparseIntSet :=
  { flags := upd s.flags value true, elements := s.elements ++ [value] }

/-- Method `insert`. -/
def insert (s : SparseIntSet) (value : Int) : SparseIntSet :=
  if s.contains value then s else s.insert_without_checking_existance value

/-- Method `clear`. -/
def clear (s : SparseIntSet) : SparseIntSet :=
  { flags := s.elements.foldl (fun f value => upd f value false) s.flags, elements := [] }

/-- Method `get_elements`. -/
def get_elements (s : SparseIntSet) : List Int := s.elements

end SparseIntSet

/-- The members of the class `MoveGenerators` that its constructor and
`set_active_percentage` read and write. -/
structure MoveGenerators where
  max_num_neighbors : Nat
  moves : List (Int × Int)
  edge_costs : List Int
  base_move_indices_involving : Int → List Nat
  active_move_indices_involving_1st : Int → List Nat
  current_num_neighbors : Int → Nat
  move_active_in_1st : Nat → Bool
  move_active_in_2nd : Nat → Bool
  vertices_getting_updated : List Int
  vertices_in_updated_moves : SparseIntSet
  unique_move_generators : List Nat
  unique_endpoints : SparseIntSet

namespace MoveGenerators

/-- The members as the initializer list and the `resize` calls of the constructor leave
them, before its loops. -/
def init (I : Instance) (k : Nat) : MoveGenerators :=
  { max_num_neighbors := min k (I.vertices_num - 1)
    moves := []
    edge_costs := []
    base_move_indices_involving := fun _ => []
    active_move_indices_involving_1st := fun _ => []
    current_num_neighbors := fun _ => 0
    move_active_in_1st := fun _ => false
    move_active_in_2nd := fun _ => false
    vertices_getting_updated := []
    vertices_in_updated_moves := SparseIntSet.create
    unique_move_generators := []
    unique_endpoints := SparseIntSet.create }

/-- Method `get`. -/
def get (mg : MoveGenerators) (idx : Nat) : Int × Int := mg.moves.getD idx (0, 0)

/-- Method `get_edge_cost`, of the move at index `idx`. -/
def get_edge_cost (mg : MoveGenerators) (idx : Nat) : Int := mg.edge_costs.getD (idx / 2) 0

/-- Method `size`. -/
def size (mg : MoveGenerators) : Nat := mg.moves.length

/-- Assignment `base_move_indices_involving[v] = l`. -/
def set_base (mg : MoveGenerators) (v : Int) (l : List Nat) : MoveGenerators :=
  { mg with base_move_indices_involving := upd mg.base_move_indices_involving v l }

/-- Statements `moves.emplace_back(a, b); moves.emplace_back(b, a);
edge_costs.emplace_back(cost)`. -/
def push_moves (mg : MoveGenerators) (cost : Int) (a b : Int) : MoveGenerators :=
  { mg with moves := mg.moves ++ [(a, b), (b, a)], edge_costs := mg.edge_costs ++ [cost] }

/-- The lambda `insert` of the constructor. -/
def insert_pair (mg : MoveGenerators) (cost : Int) (a b : Int) : MoveGenerators :=
  let base_idx := mg.moves.length
  let m1 := mg.push_moves cost a b
  let m2 := m1.set_base a (m1.base_move_indices_involving a ++ [base_idx])
  m2.set_base b (m2.base_move_indices_involving b ++ [base_idx])

/-- The loop of the constructor that looks for the move `(j, i)` among the base indices of
`j`: true when it is found (`add = false`). -/
def has_pair (mg : MoveGenerators) (j i : Int) : Bool :=
  (mg.base_move_indices_involving j).any (fun idx => decide ((mg.get idx).2 = i))

/-- One pass of the inner loop of the constructor, for vertex `i` and position `p` of its
neighbour list. -/
def pair_step (I : Instance) (nb : Int → List Int) (mg : MoveGenerators) (i : Int) (p : Nat) :
    MoveGenerators :=
  let neighbors_end := 1 + mg.max_num_neighbors
  let j := (nb i).getD p 0
  let cost := I.cost i j
  if i < j then mg.insert_pair cost i j
  else
    let jneighbors := nb j
    let cij := I.cost i j
    let cjn := I.cost j (jneighbors.getD (neighbors_end - 1) 0)
    if cij > cjn then mg.insert_pair cost j i
    else if cij = cjn then
      if mg.has_pair j i then mg else mg.insert_pair cost j i
    else mg

/-- The inner loop of the constructor, for vertex `i`: `p` runs from `neighbors_begin = 1`
to `neighbors_end - 1`. -/
def pair_loop (I : Instance) (nb : Int → List Int) (mg : MoveGenerators) (i : Int) :
    MoveGenerators :=
  (List.range' 1 mg.max_num_neighbors).foldl (fun m p => pair_step I nb m i p) mg

/-- The first loop of the constructor, over the vertices. -/
def pair_loops (I : Instance) (nb : Int → List Int) (mg : MoveGenerators) : MoveGenerators :=
  (List.range I.vertices_num).foldl
    (fun (m : MoveGenerators) (i : Nat) => pair_loop I nb m (i : Int)) mg

/-- The second loop of the constructor: the base indices of every vertex are sorted by the
cost of their edge. `std::sort` returns some sorted permutation; the model takes the one of
insertion sort. -/
def sort_loop (I : Instance) (mg : MoveGenerators) : MoveGenerators :=
  (List.range I.vertices_num).foldl (fun (m : MoveGenerators) (i : Nat) =>
    m.set_base (i : Int) ((m.base_move_indices_involving (i : Int)).insertionSort
      (fun a b => m.get_edge_cost a ≤ m.get_edge_cost b))) mg

/-- Constructor `MoveGenerators(instance, k)`. -/
def create (I : Instance) (nb : Int → List Int) (k : Nat) : MoveGenerators :=
  sort_loop I (pair_loops I nb (init I k))

end MoveGenerators

/-- The vertices of a line at the positions 0, 1 and 3, with their distances. -/
def threeInstance : Instance :=
  ⟨3, fun i j => |(if i = 2 then 3 else i) - (if j = 2 then 3 else j)|,
    fun v => if v = 0 then 0 else 1, 10⟩

/-- The neighbour lists of `threeInstance`. -/
def threeNb : Int → List Int :=
  fun v => if v = 0 then [0, 1, 2] else if v = 1 then [1, 0, 2] else [2, 1, 0]

/-- The registry that the constructor builds for `threeInstance` with `k = 1`. -/
def threeMoves : MoveGenerators := MoveGenerators.create threeInstance threeNb 1

/-- What the constructor of `MoveGenerators` expects of the neighbour lists, for the `K`
neighbours it reads: the list of `v` begins with `v`, has more than `K` entries, which are
distinct vertices, is sorted by increasing cost from `v`, and holds the nearest vertices: a
vertex that is not in the list is at least as far from `v` as those that are. -/
structure NbOK (I : Instance) (nb : Int → List Int) (K : Nat) : Prop where
  len : ∀ v, 0 ≤ v → v < (I.vertices_num : Int) → K < (nb v).length
  head : ∀ v, 0 ≤ v → v < (I.vertices_num : Int) → (nb v).getD 0 0 = v
  nodup : ∀ v, 0 ≤ v → v < (I.vertices_num : Int) → (nb v).Nodup
  range : ∀ v, 0 ≤ v → v < (I.vertices_num : Int) → ∀ u ∈ nb v,
    0 ≤ u ∧ u < (I.vertices_num : Int)
  sorted : ∀ v, 0 ≤ v → v < (I.vertices_num : Int) → ∀ p q, p ≤ q → q < (nb v).length →
    I.cost v ((nb v).getD p 0) ≤ I.cost v ((nb v).getD q 0)
  nearest : ∀ v, 0 ≤ v → v < (I.vertices_num : Int) → ∀ u, 0 ≤ u →
    u < (I.vertices_num : Int) → u ∉ nb v → ∀ w ∈ nb v, I.cost v w ≤ I.cost v u

/-- Invariant of the first loop of the constructor, `D x q` saying that position `q` of
the neighbour list of `x` has been processed: the moves come in twins `(a, b)`, `(b, a)`
with `a < b`, the base indices of a vertex are the even indices of the moves it is an
endpoint of, no pair occurs twice, and the pairs present are those of the processed
positions. -/
structure PairsInv (nb : Int → List Int) (mg : MoveGenerators) (D : Int → Nat → Prop) :
    Prop where
  len : mg.moves.length = 2 * mg.edge_costs.length
  shape : ∀ m, m < mg.edge_costs.length →
    ∃ a b, a < b ∧ mg.moves[2 * m]? = some (a, b) ∧ mg.moves[2 * m + 1]? = some (b, a)
  base_iff : ∀ v idx, idx ∈ mg.base_move_indices_involving v ↔
    ∃ m a b, idx = 2 * m ∧ mg.moves[2 * m]? = some (a, b) ∧ (v = a ∨ v = b)
  base_nodup : ∀ v, (mg.base_move_indices_involving v).Nodup
  uniq : ∀ m m2 a b, mg.moves[2 * m]? = some (a, b) → mg.moves[2 * m2]? = some (a, b) →
    m = m2
  present : ∀ a b, a < b → ((∃ m, mg.moves[2 * m]? = some (a, b)) ↔
    ∃ x q, D x q ∧ ((x = a ∧ (nb x).getD q 0 = b) ∨ (x = b ∧ (nb x).getD q 0 = a)))

/-- The positions of the neighbour lists that the first loop of the constructor has
processed when it is about to process position `p` of the list of vertex `i`. -/
def Done (K : Nat) (i : Int) (p : Nat) : Int → Nat → Prop :=
  fun x q => 0 ≤ x ∧ 1 ≤ q ∧ q ≤ K ∧ (x < i ∨ (x = i ∧ q < p))

/-! ## The active move generators

Shallow embedding of `MoveGenerators::set_active_percentage` and of the methods it calls. A
move is passed by its index `idx` in `moves`, so that the slot `(&move - moves.data()) / 2`
of its two activity flags is `idx / 2`. The number
`std::round(percentage[vertex] * max_num_neighbors)`, a floating-point expression, is the
value `num vertex` of a parameter `num` of the model. -/

namespace MoveGenerators

/-- Static method `get_twin_move_generator_index`: `index ^ 1`. -/
def get_twin_move_generator_index (index : Nat) : Nat := index ^^^ 1

/-- Method `get_move_generator_indices_involving_1st`. -/
def get_move_generator_indices_involving_1st (mg : MoveGenerators) (vertex : Int) : List Nat :=
  mg.active_move_indices_involving_1st vertex

/-- Method `is_active_in`. -/
def is_active_in (mg : MoveGenerators) (idx : Nat) (vertex : Int) : Bool :=
  if vertex = (mg.get idx).1 then mg.move_active_in_1st (idx / 2)
  else mg.move_active_in_2nd (idx / 2)

/-- Method `is_active_in_any`. -/
def is_active_in_any (mg : MoveGenerators) (idx : Nat) : Bool :=
  mg.move_active_in_1st (idx / 2) || mg.move_active_in_2nd (idx / 2)

/-- Method `set_active_in`. -/
def set_active_in (mg : MoveGenerators) (idx : Nat) (vertex : Int) : MoveGenerators :=
  if vertex = (mg.get idx).1 then
    { mg with move_active_in_1st := upd mg.move_active_in_1st (idx / 2) true }
  else { mg with move_active_in_2nd := upd mg.move_active_in_2nd (idx / 2) true }

/-- Method `set_not_active_in`. -/
def set_not_active_in (mg : MoveGenerators) (idx : Nat) (vertex : Int) : MoveGenerators :=
  if vertex = (mg.get idx).1 then
    { mg with move_active_in_1st := upd mg.move_active_in_1st (idx / 2) false }
  else { mg with move_active_in_2nd := upd mg.move_active_in_2nd (idx / 2) false }

/-- Statements `vertices_in_updated_moves.insert(move.get_first_vertex());
vertices_in_updated_moves.insert(move.get_second_vertex())`. -/
def note_updated (mg : MoveGenerators) (idx : Nat) : MoveGenerators :=
  { mg with vertices_in_updated_moves :=
      (mg.vertices_in_updated_moves.insert (mg.get idx).1).insert (mg.get idx).2 }

/-- Statements `vertices_getting_updated.clear(); vertices_in_updated_moves.clear()`. -/
def clear_updated (mg : MoveGenerators) : MoveGenerators :=
  { mg with
    vertices_getting_updated := [],
    vertices_in_updated_moves := mg.vertices_in_updated_moves.clear }

/-- Statement `vertices_getting_updated.push_back(vertex)`. -/
def push_getting_updated (mg : MoveGenerators) (vertex : Int) : MoveGenerators :=
  { mg with vertices_getting_updated := mg.vertices_getting_updated ++ [vertex] }

/-- Assignment `current_num_neighbors[vertex] = num_neigbors`. -/
def set_current (mg : MoveGenerators) (vertex : Int) (num_neigbors : Nat) : MoveGenerators :=
  { mg with current_num_neighbors := upd mg.current_num_neighbors vertex num_neigbors }

/-- Statements `unique_move_generators.clear(); unique_endpoints.clear()`. -/
def clear_unique (mg : MoveGenerators) : MoveGenerators :=
  { mg with
    unique_move_generators := [],
    unique_endpoints := mg.unique_endpoints.clear }

/-- Statements `unique_endpoints.insert_without_checking_existance(j);
unique_move_generators.push_back(idx)`. -/
def push_unique (mg : MoveGenerators) (j : Int) (idx : Nat) : MoveGenerators :=
  { mg with
    unique_endpoints := mg.unique_endpoints.insert_without_checking_existance j,
    unique_move_generators := mg.unique_move_generators ++ [idx] }

/-- Assignment `active_move_indices_involving_1st[vertex] = l`. -/
def set_active_list (mg : MoveGenerators) (vertex : Int) (l : List Nat) : MoveGenerators :=
  { mg with
    active_move_indices_involving_1st := upd mg.active_move_indices_involving_1st vertex l }

/-- Body of the loop of `set_active_percentage` that deactivates position `n` of the base
indices of `vertex`. -/
def deactivate_step (mg : MoveGenerators) (vertex : Int) (n : Nat) : MoveGenerators :=
  let idx := (mg.base_move_indices_involving vertex).getD n 0
  (mg.set_not_active_in idx vertex).note_updated idx

/-- Body of the loop of `set_active_percentage` that activates position `n` of the base
indices of `vertex`. -/
def activate_step (mg : MoveGenerators) (vertex : Int) (n : Nat) : MoveGenerators :=
  let idx := (mg.base_move_indices_involving vertex).getD n 0
  (mg.set_active_in idx vertex).note_updated idx

/-- Body of the first loop of `set_active_percentage`, for `vertex`; `num_neigbors` is the
rounded number of neighbours to consider. -/
def update_vertex (mg : MoveGenerators) (num_neigbors : Nat) (vertex : Int) : MoveGenerators :=
  if num_neigbors = mg.current_num_neighbors vertex then mg
  else
    let m1 := mg.push_getting_updated vertex
    let m2 :=
      if num_neigbors < mg.current_num_neighbors vertex then
        (List.range' num_neigbors (mg.current_num_neighbors vertex - num_neigbors)).foldl
          (fun m n => m.deactivate_step vertex n) m1
      else
        (List.range' (mg.current_num_neighbors vertex)
          (num_neigbors - mg.current_num_neighbors vertex)).foldl
          (fun m n => m.activate_step vertex n) m1
    m2.set_current vertex num_neigbors

/-- Body of the loop over the base indices of `vertex` in the second loop of
`set_active_percentage`. -/
def rebuild_step (mg : MoveGenerators) (vertex : Int) (base_idx : Nat) : MoveGenerators :=
  if !mg.is_active_in_any base_idx then mg
  else
    let idx := if vertex = (mg.get base_idx).1 then base_idx
      else get_twin_move_generator_index base_idx
    let j := (mg.get idx).2
    if !mg.unique_endpoints.contains j then mg.push_unique j idx else mg

/-- Body of the second loop of `set_active_percentage`, for `vertex`. -/
def rebuild_vertex (mg : MoveGenerators) (vertex : Int) : MoveGenerators :=
  let m1 := mg.clear_unique
  let m2 := (m1.base_move_indices_involving vertex).foldl
    (fun m base_idx => m.rebuild_step vertex base_idx) m1
  m2.set_active_list vertex m2.unique_move_generators

/-- Method `set_active_percentage(percentage, vertices)`, with `num vertex` for
`std::round(percentage[vertex] * max_num_neighbors)`. -/
def set_active_percentage (mg : MoveGenerators) (num : Int → Nat) (vertices : List Int) :
    MoveGenerators :=
  let m1 := vertices.foldl (fun m vertex => m.update_vertex (num vertex) vertex) mg.clear_updated
  let m2 := m1.clear_unique
  m2.vertices_in_updated_moves.get_elements.foldl (fun m vertex => m.rebuild_vertex vertex) m2

/-- The index, among the base index `b` and its twin, of the move with first vertex `v`. -/
def orient (mg : MoveGenerators) (v : Int) (b : Nat) : Nat :=
  if v = (mg.get b).1 then b else get_twin_move_generator_index b

/-- The moves involving `v` that are active in at least one of their two endpoint roles, in
the order of the base indices of `v`, each by its index with first vertex `v`. -/
def oriented (mg : MoveGenerators) (v : Int) : List Nat :=
  ((mg.base_move_indices_involving v).filter (fun b => mg.is_active_in_any b)).map
    (fun b => mg.orient v b)

end MoveGenerators

/-- The flags of a `SparseIntSet` are those of its elements. -/
def SparseIntSet.OK (s : SparseIntSet) : Prop := ∀ v, s.flags v = true ↔ v ∈ s.elements

/-- The registries `mg2` and `mg` have the same moves, edge costs and base indices. -/
def MoveGenerators.Same (mg2 mg : MoveGenerators) : Prop :=
  mg2.moves = mg.moves ∧ mg2.edge_costs = mg.edge_costs ∧
  mg2.base_move_indices_involving = mg.base_move_indices_involving ∧
  mg2.max_num_neighbors = mg.max_num_neighbors

/-- The registry `r` has the moves, base indices, activity flags, numbers of neighbours and
set `vertices_in_updated_moves` of `m`. -/
def MoveGenerators.Kept (r m : MoveGenerators) : Prop :=
  r.Same m ∧ r.move_active_in_1st = m.move_active_in_1st ∧
  r.move_active_in_2nd = m.move_active_in_2nd ∧
  r.current_num_neighbors = m.current_num_neighbors ∧
  r.vertices_in_updated_moves = m.vertices_in_updated_moves

/-- The activity data of a registry. -/
def MoveGenerators.activity (mg : MoveGenerators) :
    (Int → Nat) × (Nat → Bool) × (Nat → Bool) × (Int → List Nat) × SparseIntSet ×
      SparseIntSet :=
  (mg.current_num_neighbors, mg.move_active_in_1st, mg.move_active_in_2nd,
    mg.active_move_indices_involving_1st, mg.vertices_in_updated_moves, mg.unique_endpoints)

/-- Invariant of the activity data of a registry, `num v` being the number of neighbours
last requested for `v`: the move at position `n` of the base indices of `v` is active in the
role of `v` exactly when `n < num v`, and the active list of `v` holds the moves involving
`v` that are active in one of the two roles. -/
structure ActiveOK (mg : MoveGenerators) (num : Int → Nat) : Prop where
  current : ∀ v, mg.current_num_neighbors v = num v
  bound : ∀ v, num v ≤ (mg.base_move_indices_involving v).length
  flags : ∀ v n, n < (mg.base_move_indices_involving v).length →
    (mg.is_active_in ((mg.base_move_indices_involving v).getD n 0) v = true ↔ n < num v)
  updated : mg.vertices_in_updated_moves.OK
  endpoints : mg.unique_endpoints.OK
  lists : ∀ v, mg.active_move_indices_involving_1st v = mg.oriented v

/-- The registries reached from the one the constructor builds by calls of
`set_active_percentage` for vertices of the instance and numbers of neighbours up to
`max_num_neighbors`, which is what percentages between 0 and 1 give; `num v` is the number
requested by the latest call that lists `v`, or 0. -/
inductive ActiveReach (I : Instance) (nb : Int → List Int) (k : Nat) :
    MoveGenerators → (Int → Nat) → Prop
  | init : ActiveReach I nb k (MoveGenerators.create I nb k) (fun _ => 0)
  | step (mg : MoveGenerators) (num num2 : Int → Nat) (vertices : List Int) :
      ActiveReach I nb k mg num →
      (∀ v ∈ vertices, 0 ≤ v ∧ v < (I.vertices_num : Int) ∧ num2 v ≤ mg.max_num_neighbors) →
      ActiveReach I nb k (mg.set_active_percentage num2 vertices)
        (fun v => if v ∈ vertices then num2 v else num v)

/-- The registry of `threeInstance` after `set_active_percentage` has activated the one
neighbour of the vertices 0 and 1 and then deactivated that of vertex 1. -/
def threeActive : MoveGenerators :=
  (threeMoves.set_active_percentage (fun _ => 1) [0, 1]).set_active_percentage (fun _ => 0) [1]

/-- The common form of `set_active_in` (`b = true`) and `set_not_active_in` (`b = false`). -/
def MoveGenerators.set_flag (mg : MoveGenerators) (idx : Nat) (vertex : Int) (b : Bool) :
    MoveGenerators :=
  if vertex = (mg.get idx).1 then
    { mg with move_active_in_1st := upd mg.move_active_in_1st (idx / 2) b }
  else { mg with move_active_in_2nd := upd mg.move_active_in_2nd (idx / 2) b }

/-- The common form of `activate_step` (`b = true`) and `deactivate_step` (`b = false`). -/
def MoveGenerators.toggle_step (b : Bool) (mg : MoveGenerators) (vertex : Int) (n : Nat) :
    MoveGenerators :=
  let idx := (mg.base_move_indices_involving vertex).getD n 0
  (mg.set_flag idx vertex b).note_updated idx

/-- Invariant of the first loop of `set_active_percentage`, which started in `m0`: the
moves, base indices, active lists and `unique_endpoints` are those of `m0`, `A v n` tells
whether position `n` of the base indices of `v` is active in the role of `v`, and the
endpoints of a move with a changed flag are in `vertices_in_updated_moves`. -/
structure Toggling (m0 m : MoveGenerators) (A : Int → Nat → Prop) : Prop where
  same : m.Same m0
  lists : m.active_move_indices_involving_1st = m0.active_move_indices_involving_1st
  endpoints : m.unique_endpoints = m0.unique_endpoints
  flags : ∀ v n, n < (m.base_move_indices_involving v).length →
    (m.is_active_in ((m.base_move_indices_involving v).getD n 0) v = true ↔ A v n)
  updated : m.vertices_in_updated_moves.OK
  changed : ∀ j, (m.move_active_in_1st j ≠ m0.move_active_in_1st j ∨
      m.move_active_in_2nd j ≠ m0.move_active_in_2nd j) →
    m.vertices_in_updated_moves.flags (m.get (2 * j)).1 = true ∧
    m.vertices_in_updated_moves.flags (m.get (2 * j)).2 = true

/-- The numbers of neighbours last requested in `threeActive`: 1 for vertex 0, 0 for the
vertices 1 and 2. -/
def threeNum : Int → Nat := fun v => if v ∈ [1] then 0 else if v ∈ [0, 1] then 1 else 0

/-! ## OneOneExchange

Shallow embedding of `src/localsearch/OneOneExchange.hpp`. A move generator is given by its
vertices `i` and `j`; `edge_cost` stands for `moves.get_edge_cost(move)`. The writes of
`execute` to `storage` and to `update_bits`, which the solution does not read, are left
out. -/

/-- Method `get_route_index(customer)`. -/
def Solution.get_route_index (s : Solution) (customer : Int) : Nat :=
  (s.customers_list customer).route_ptr

/-- Method `get_route_index(vertex, fallback)`. -/
def Solution.get_route_index_fallback (s : Solution) (vertex fallback : Int) : Nat :=
  if vertex = 0 then (s.customers_list fallback).route_ptr
  else (s.customers_list vertex).route_ptr

/-- Method `get_next_vertex(customer)`. -/
def Solution.get_next_customer_vertex (s : Solution) (customer : Int) : Int :=
  (s.customers_list customer).next

/-- Method `get_prev_vertex(customer)`. -/
def Solution.get_prev_customer_vertex (s : Solution) (customer : Int) : Int :=
  (s.customers_list customer).prev

/-- Method `get_cost_prev_customer`. -/
def Solution.get_cost_prev_customer (s : Solution) (customer : Int) : Int :=
  (s.customers_list customer).c_prev_curr

/-- Method `get_cost_prev_depot`. -/
def Solution.get_cost_prev_depot (s : Solution) (route : Nat) : Int :=
  (s.routes_list route).c_prev_curr

namespace OneOneExchange

/-- Method `compute_cost(solution, move)`. -/
def compute_cost (I : Instance) (s : Solution) (i j : Int) : Int :=
  let iRoute := s.get_route_index_fallback i j
  let jRoute := s.get_route_index_fallback j i
  let iPrev := s.get_prev_vertex iRoute i
  let iNext := s.get_next_vertex iRoute i
  let jPrev := s.get_prev_vertex jRoute j
  let jPrevPrev := s.get_prev_vertex jRoute jPrev
  let iRem := -s.get_cost_prev_vertex iRoute i - s.get_cost_prev_vertex iRoute iNext
  let jPrevRem := -s.get_cost_prev_vertex jRoute jPrev - s.get_cost_prev_vertex jRoute j
  let iAdd := I.cost jPrevPrev i + I.cost i j
  let jPrevAdd := I.cost iPrev jPrev + I.cost jPrev iNext
  iAdd + jPrevAdd + iRem + jPrevRem

/-- Method `is_feasible(solution, move)`. -/
def is_feasible (I : Instance) (s : Solution) (i j : Int) : Bool :=
  let i_route := s.get_route_index_fallback i j
  let j_route := s.get_route_index_fallback j i
  let j_prev := s.get_prev_vertex j_route j
  (decide (i_route ≠ j_route) && decide (j_prev ≠ 0) &&
    decide (s.get_route_load i_route - I.demand i + I.demand j_prev ≤ I.vehicle_capacity) &&
    decide (s.get_route_load j_route - I.demand j_prev + I.demand i ≤ I.vehicle_capacity)) ||
  (decide (i_route = j_route) && decide (i ≠ j_prev) &&
    decide (j_prev ≠ s.get_next_vertex i_route i))

/-- Method `execute(solution, move, storage)`. -/
def execute (I : Instance) (s : Solution) (i j : Int) : Solution :=
  let iRoute := s.get_route_index_fallback i j
  let jRoute := s.get_route_index_fallback j i
  let iNext := s.get_next_vertex iRoute i
  let jPrev := s.get_prev_vertex jRoute j
  let s1 := (Solution.remove_vertex I s true iRoute i).1
  let s2 := Solution.insert_vertex_before I s1 true jRoute j i
  let s3 := (Solution.remove_vertex I s2 true jRoute jPrev).1
  Solution.insert_vertex_before I s3 true iRoute iNext jPrev

/-- The struct `Cache12`. -/
structure Cache12 where
  v : Int
  prev : Int
  next : Int
  prevprev : Int
  vrem : Int
  prevrem : Int

/-- Method `prepare_cache12(solution, vertex)`, for a customer. -/
def prepare_cache12 (s : Solution) (vertex : Int) : Cache12 :=
  let prev := s.get_prev_customer_vertex vertex
  let next := s.get_next_customer_vertex vertex
  let route := s.get_route_index vertex
  { v := vertex
    prev := prev
    next := next
    prevprev := s.get_prev_vertex route prev
    vrem := -s.get_cost_prev_customer vertex - s.get_cost_prev_vertex route next
    prevrem := -s.get_cost_prev_vertex route prev - s.get_cost_prev_customer vertex }

/-- Method `prepare_cache12(solution, vertex, backup)`, for the depot. -/
def prepare_cache12_backup (s : Solution) (vertex backup : Int) : Cache12 :=
  let route := s.get_route_index backup
  let prev := s.get_last_customer route
  let next := s.get_first_customer route
  { v := vertex
    prev := prev
    next := next
    prevprev := s.get_prev_customer_vertex prev
    vrem := -s.get_cost_prev_depot route - s.get_cost_prev_customer next
    prevrem := -s.get_cost_prev_customer prev - s.get_cost_prev_depot route }

/-- The cache that the local search prepares for the endpoint `vertex` of a move whose other
endpoint is `other`: `prepare_cache12(solution, vertex, other)` for the depot,
`prepare_cache12(solution, vertex)` for a customer. -/
def cache_of (s : Solution) (vertex other : Int) : Cache12 :=
  if vertex = 0 then prepare_cache12_backup s vertex other else prepare_cache12 s vertex

/-- Method `compute_cost_pair(move, i, j)`. -/
def compute_cost_pair (I : Instance) (edge_cost : Int) (i j : Cache12) : Int × Int :=
  let c_iv_jv := edge_cost
  let c_iprev_jprev := I.cost i.prev j.prev
  let delta1 := I.cost j.prevprev i.v + c_iv_jv + c_iprev_jprev + I.cost j.prev i.next +
    i.vrem + j.prevrem
  let delta2 := I.cost i.prevprev j.v + c_iv_jv + c_iprev_jprev + I.cost i.prev j.next +
    j.vrem + i.prevrem
  (delta1, delta2)

/-- Method template `compute_cost(move, i, j)` on two caches; it reads `v`, `prev`, `next`
and `vrem` of `i` and `prev`, `prevprev` and `prevrem` of `j`, which the structs `Cache1` and
`Cache2` hold with the values that `Cache12` gives them. -/
def compute_cost_cached (I : Instance) (edge_cost : Int) (i j : Cache12) : Int :=
  I.cost j.prevprev i.v + edge_cost + I.cost i.prev j.prev + I.cost j.prev i.next +
    i.vrem + j.prevrem

end OneOneExchange

/-- The solution of `lineInstance` with the single route `1: depot, 1, 2, 3, depot`. -/
def lineThree : Solution := Solution.insert_vertex_before lineInstance lineTwo false 1 0 3

/-- The cyclic list describing route 1 of `lineThree`. -/
def lineThreeA : Nat → List Int := upd lineTwoA 1 [3, 0, 1, 2]

/-- The solution of `lineInstance` with the routes `1: depot, 1, depot` and
`2: depot, 2, 3, depot`. -/
def lineSplit : Solution := Solution.insert_vertex_before lineInstance lineBoth false 2 0 3

/-- The cyclic lists describing the routes of `lineSplit`. -/
def lineSplitA : Nat → List Int := upd lineBothA 2 [3, 0, 2]

/-- The edge cost stored for the pair at the indices `2 * m` and `2 * m + 1` is the cost of
the arc between its vertices. -/
def MoveGenerators.CostsOK (I : Instance) (mg : MoveGenerators) : Prop :=
  mg.moves.length = 2 * mg.edge_costs.length ∧
  ∀ m a b, mg.moves[2 * m]? = some (a, b) → mg.edge_costs[m]? = some (I.cost a b)

/-! ## The route pool holds every absent route -/

/-- Every route index of `1 .. max_number_routes - 1` that is not in the solution is stored
in the live part of the route pool. -/
def PoolFull (s : Solution) (A : Nat → List Int) : Prop :=
  ∀ r, 0 < r → r < s.max_number_routes → A r = [] →
    ∃ i, s.routes_pool.begin ≤ i ∧ i < s.routes_pool.capacity ∧ s.routes_pool.array i = r

/-! ## Clarke and Wright savings

Shallow embedding of `src/solution/savings.hpp`. The neighbour lists `get_neighbors_of` are
the parameter `nb`. The weight `lambda` is the rational `lnum / lden` with `0 < lden`; the
value of a saving is kept multiplied by `lden`, which does not change the order of the
values. `std::sort` leaves savings of equal value in an unspecified order; the model sorts
by insertion, and the theorems about the merging loop hold for every order of the
savings. -/

/-- The struct `Saving`. -/
structure Saving where
  i : Int
  j : Int
  value : Int
deriving DecidableEq

namespace Savings

/-- The loop `for i in customers: build_one_customer_route<false>(i)`, for the customers
`1 .. n`. -/
def build_all (I : Instance) (s : Solution) : Nat → Solution
  | 0 => s
  | n + 1 => (Solution.build_one_customer_route I (build_all I s n) false ((n : Int) + 1)).2

/-- The inner loop over the neighbours of `i`, entered with the neighbours from position
`n` on in `rest`; `limit` is `static_cast<unsigned int>(neighbors_num)`. -/
def savings_inner (I : Instance) (lnum lden : Int) (limit : Int) (i : Int) :
    List Int → Nat → List Saving → List Saving
  | [], _, acc => acc
  | j :: rest, added, acc =>
    if (added : Int) < limit then
      if i < j then
        savings_inner I lnum lden limit i rest (added + 1)
          (acc ++ [⟨i, j, lden * (I.cost i 0 + I.cost 0 j) - lnum * I.cost i j⟩])
      else savings_inner I lnum lden limit i rest added acc
    else acc

/-- The loop over the customers `1 .. n` that fills the vector `savings`. -/
def savings_outer (I : Instance) (nb : Int → List Int) (lnum lden : Int) (limit : Int) :
    Nat → List Saving
  | 0 => []
  | n + 1 =>
    savings_inner I lnum lden limit ((n : Int) + 1) (nb ((n : Int) + 1)).tail 0
      (savings_outer I nb lnum lden limit n)

/-- The call of `std::sort` with the comparator `a.value > b.value`. -/
def sort_savings (l : List Saving) : List Saving :=
  l.insertionSort (fun a b => b.value ≤ a.value)

/-- The body of the merging loop for one saving. -/
def merge_step (I : Instance) (fuel : Nat) (s : Solution) (sv : Saving) : Option Solution :=
  let i := sv.i
  let j := sv.j
  let iRoute := s.get_route_index i
  let jRoute := s.get_route_index j
  if iRoute = jRoute then some s
  else if s.get_last_customer iRoute = i ∧ s.get_first_customer jRoute = j ∧
      s.get_route_load iRoute + s.get_route_load jRoute ≤ I.vehicle_capacity then
    s.append_route I iRoute jRoute fuel
  else if s.get_last_customer jRoute = j ∧ s.get_first_customer iRoute = i ∧
      s.get_route_load iRoute + s.get_route_load jRoute ≤ I.vehicle_capacity then
    s.append_route I jRoute iRoute fuel
  else some s

/-- The merging loop over the sorted savings. -/
def merge_loop (I : Instance) (fuel : Nat) : List Saving → Solution → Option Solution
  | [], s => some s
  | sv :: rest, s =>
    match merge_step I fuel s sv with
    | some s1 => merge_loop I fuel rest s1
    | none => none

/-- The value `savings_num = customers_num * min(customers_num - 1, neighbors_num)`, the
product of two values of type `int`. -/
def savings_num (I : Instance) (neighbors_num : Int) : Int :=
  ((I.vertices_num : Int) - 1) * min ((I.vertices_num : Int) - 1 - 1) neighbors_num

/-- The vector `savings` after the sort, or `none` when the function does not get there:
the call `savings.reserve(static_cast<unsigned long>(savings_num))` throws
`std::length_error` for a negative `savings_num`, which converts to a value above
`max_size()`, and a product `savings_num` outside the range of `int` is undefined. -/
def sorted_savings (I : Instance) (nb : Int → List Int) (lnum lden : Int)
    (neighbors_num : Int) : Option (List Saving) :=
  if 0 ≤ savings_num I neighbors_num ∧ savings_num I neighbors_num < 2147483648 then
    some (sort_savings (savings_outer I nb lnum lden
      ((min ((I.vertices_num : Int) - 1 - 1) neighbors_num) % 4294967296) (I.vertices_num - 1)))
  else none

/-- The function `clarke_and_wright(instance, solution, lambda, neighbors_num)`; the result
is `none` when `savings.reserve` throws (or the loops run out of fuel). -/
def clarke_and_wright (I : Instance) (nb : Int → List Int) (s : Solution) (lnum lden : Int)
    (neighbors_num : Int) (fuel : Nat) : Option Solution :=
  match s.reset I fuel with
  | some s0 =>
    match sorted_savings I nb lnum lden neighbors_num with
    | some savings => merge_loop I fuel savings (build_all I s0 (I.vertices_num - 1))
    | none => none
  | none => none

/-- The bound `2 * sum of cost(depot, i)` over the customers `1 .. n`: the cost of the
solution that serves each of them by a route of its own. -/
def singles_cost (I : Instance) : Nat → Int
  | 0 => 0
  | n + 1 => singles_cost I n + 2 * I.cost 0 ((n : Int) + 1)

/-- The cycles of the solution with one route per customer `1 .. n`, customer `c` in
route `c`. -/
def singles (n : Nat) : Nat → List Int :=
  fun r => if 0 < r ∧ r ≤ n then [0, (r : Int)] else []

end Savings

/-- An instance with rounded Euclidean costs: the depot at `(0, 0)`, customer 1 at `(1, 1)`
and customer 2 at `(-1, -1)`. The distances from the depot are `sqrt 2`, rounded to 1, the
distance of the customers is `sqrt 8`, rounded to 3. Demands are 1, the capacity is 2. -/
def roundInstance : Instance :=
  ⟨3, fun i j => if i = j then 0 else if i = 0 ∨ j = 0 then 1 else 3,
    fun v => if v = 0 then 0 else 1, 2⟩

/-- The neighbour lists of `roundInstance`, every vertex followed by the others in the
order of their distance. -/
def roundNb : Int → List Int :=
  fun v => if v = 0 then [0, 1, 2] else if v = 1 then [1, 0, 2] else [2, 0, 1]

/-- The neighbour lists of `lineInstance`. -/
def lineNb : Int → List Int :=
  fun v => if v = 0 then [0, 1, 2, 3] else if v = 1 then [1, 0, 2, 3]
    else if v = 2 then [2, 1, 3, 0] else [3, 2, 1, 0]

/-- Invariant of the merging loop of `clarke_and_wright`: the solution is consistent, every
present route is a cycle through the depot with at least one customer, every customer is
served, and every route respects the capacity. -/
structure Savings.Merged (I : Instance) (s : Solution) (A : Nat → List Int) : Prop where
  rep : Rep I s A
  cost : CostOK I s A
  shape : ∀ r, A r ≠ [] → ∃ t, A r = 0 :: t ∧ t ≠ []
  served : ∀ c : Int, 0 < c → c < (I.vertices_num : Int) → ∃ r, c ∈ A r
  cap : ∀ r, A r ≠ [] → loadOf I (A r) ≤ I.vehicle_capacity

/-! ## RuinAndRecreate

Shallow embedding of `src/opt/RuinAndRecreate.hpp`. The random engine is replaced by its
outcomes: the seed customer `seed`, the coins `coin1 n` (drawn next to the test of the route
size) and `coin2 n` (drawn in the branch taken) of iteration `n` of the ruin loop, the
number `strategy` of the ordering of the removed customers and the permutation `shuffle` of
`std::shuffle`. `std::sort` is an insertion sort. The neighbour lists
`Instance::get_neighbors_of` are a parameter `nb`. The initial value
`std::numeric_limits<double>::max()` of `best_cost` is `none`: it is greater than every
cost. The members `removed` and `routes` of the object are part of the state. -/

namespace RuinAndRecreate

/-- The loops `for m = 1; m < neighbors.size(); m++` of the ruin phase: the first neighbour
of `curr` that is a customer of the solution and, when `unvisited` is set, whose route is
not in `routes`; `dummy_vertex` when there is none. -/
def jump (nb : Int → List Int) (s : Solution) (routes : SparseIntSet) (unvisited : Bool)
    (curr : Int) : Int :=
  match (nb curr).tail.find? (fun neighbor =>
      !(decide (neighbor = 0) || !(s.is_customer_in_solution neighbor) ||
        (unvisited && routes.contains ((s.get_route_index neighbor : Nat) : Int)))) with
  | some neighbor => neighbor
  | none => -1

/-- The choice of the next customer to remove, after `curr` of route `route`. -/
def choose_next (nb : Int → List Int) (s : Solution) (routes : SparseIntSet) (c1 c2 : Bool)
    (route : Nat) (curr : Int) : Int :=
  if s.get_route_size route > 1 ∧ c1 = true then
    if c2 = true then
      if s.get_next_customer_vertex curr = 0 then
        s.get_next_vertex route (s.get_next_customer_vertex curr)
      else s.get_next_customer_vertex curr
    else
      if s.get_prev_customer_vertex curr = 0 then
        s.get_prev_vertex route (s.get_prev_customer_vertex curr)
      else s.get_prev_customer_vertex curr
  else jump nb s routes c2 curr

/-- The ruin loop `for n = 0; n < N; n++`, entered at iteration `n` with `m` iterations
left; the state is the solution, `removed`, `routes` and `curr`. -/
def ruin (I : Instance) (nb : Int → List Int) (coin1 coin2 : Nat → Bool) :
    Nat → Nat → Solution → List Int → SparseIntSet → Int → Solution × List Int × SparseIntSet
  | 0, _, s, removed, routes, _ => (s, removed, routes)
  | m + 1, n, s, removed, routes, curr =>
    let route := s.get_route_index curr
    let removed1 := removed ++ [curr]
    let routes1 := routes.insert ((route : Nat) : Int)
    let next := choose_next nb s routes1 (coin1 n) (coin2 n) route curr
    let s1 := (Solution.remove_vertex I s true route curr).1
    let s2 := if s1.is_route_empty route = true then s1.remove_route true route else s1
    if next = -1 then (s2, removed1, routes1)
    else ruin I nb coin1 coin2 m (n + 1) s2 removed1 routes1 next

/-- The `switch` that orders the removed customers. -/
def arrange (I : Instance) (strategy : Nat) (shuffle : List Int → List Int)
    (removed : List Int) : List Int :=
  match strategy with
  | 0 => shuffle removed
  | 1 => removed.insertionSort (fun a b => I.demand b ≤ I.demand a)
  | 2 => removed.insertionSort (fun a b => I.cost b 0 ≤ I.cost a 0)
  | 3 => removed.insertionSort (fun a b => I.cost a 0 ≤ I.cost b 0)
  | _ => removed

/-- The set `routes` after `routes.clear()` and the loop over the neighbours of `customer`:
the routes of the neighbours that are customers of the solution. -/
def collect (nb : Int → List Int) (s : Solution) (routes : SparseIntSet) (customer : Int) :
    SparseIntSet :=
  (nb customer).tail.foldl
    (fun (rs : SparseIntSet) (wh : Int) =>
      if wh = 0 ∨ s.is_customer_in_solution wh = false then rs
      else rs.insert ((s.get_route_index wh : Nat) : Int))
    routes.clear

/-- The variables `best_route`, `best_where` and `best_cost`. -/
structure Best where
  route : Nat
  wh : Int
  cost : Option Int

/-- The test `cost < best_cost`. -/
def below (cost : Int) : Option Int → Bool
  | none => true
  | some c => decide (cost < c)

/-- The statement `if (cost < best_cost) { best_cost = cost; best_route = route;
best_where = where; }`. -/
def Best.improve (b : Best) (cost : Int) (route : Nat) (wh : Int) : Best :=
  if below cost b.cost = true then ⟨route, wh, some cost⟩ else b

/-- The loop `for where = first_customer(route); where != depot; where = next(where)` over
the positions of a route, entered at `wh` with fuel for the customers of the route. -/
def scan_customers (I : Instance) (s : Solution) (customer : Int) (route : Nat) :
    Nat → Int → Best → Option Best
  | 0, _, _ => none
  | m + 1, wh, b =>
    if wh = 0 then some b
    else
      scan_customers I s customer route m (s.get_next_customer_vertex wh)
        (b.improve (- s.get_cost_prev_customer wh +
          I.cost (s.get_prev_customer_vertex wh) customer + I.cost customer wh) route wh)

/-- The body of the loop over the candidate routes. -/
def scan_route (I : Instance) (s : Solution) (customer : Int) (fuel : Nat) (b : Best)
    (route : Nat) : Option Best :=
  if s.get_route_load route + I.demand customer > I.vehicle_capacity then some b
  else
    match scan_customers I s customer route fuel (s.get_first_customer route) b with
    | none => none
    | some b1 =>
      some (b1.improve (- s.get_cost_prev_depot route +
        I.cost (s.get_last_customer route) customer + I.cost customer 0) route 0)

/-- The loop `for (auto route : routes.get_elements())`. -/
def scan_routes (I : Instance) (s : Solution) (customer : Int) (fuel : Nat) :
    List Int → Best → Option Best
  | [], b => some b
  | route :: rest, b =>
    match scan_route I s customer fuel b route.toNat with
    | none => none
    | some b1 => scan_routes I s customer fuel rest b1

/-- The body of the recreate loop for one removed customer. -/
def recreate_step (I : Instance) (nb : Int → List Int) (fuel : Nat) (s : Solution)
    (routes : SparseIntSet) (customer : Int) : Option (Solution × SparseIntSet) :=
  match scan_routes I s customer fuel (collect nb s routes customer).get_elements
      ⟨0, -1, none⟩ with
  | none => none
  | some b =>
    if b.route = s.get_end_route ∨ below (2 * I.cost customer 0) b.cost = true then
      some ((Solution.build_one_customer_route I s true customer).2, collect nb s routes customer)
    else
      some (Solution.insert_vertex_before I s true b.route b.wh customer,
        collect nb s routes customer)

/-- The recreate loop `for (auto customer : removed)`. -/
def recreate (I : Instance) (nb : Int → List Int) (fuel : Nat) :
    List Int → Solution → SparseIntSet → Option (Solution × SparseIntSet)
  | [], s, routes => some (s, routes)
  | customer :: rest, s, routes =>
    match recreate_step I nb fuel s routes customer with
    | none => none
    | some r => recreate I nb fuel rest r.1 r.2

/-- Method `apply(solution, omega)`; returns the seed, the new solution and the members
`removed` and `routes`. -/
def apply (I : Instance) (nb : Int → List Int) (coin1 coin2 : Nat → Bool) (strategy : Nat)
    (shuffle : List Int → List Int) (fuel : Nat) (s : Solution) (routes : SparseIntSet)
    (omega : Int → Int) (seed : Int) : Option (Int × Solution × List Int × SparseIntSet) :=
  let r := ruin I nb coin1 coin2 (omega seed).toNat 0 s [] routes.clear seed
  let removed := arrange I strategy shuffle r.2.1
  match recreate I nb fuel removed r.1 r.2.2 with
  | none => none
  | some r2 => some (seed, r2.1, removed, r2.2)

end RuinAndRecreate

namespace RuinAndRecreate

/-- The cost of inserting `customer` before `wh` in route `route`: the arcs from the
predecessor of `wh` to `customer` and from `customer` to `wh` replace the arc from the
predecessor to `wh`. -/
def insertion_cost (I : Instance) (s : Solution) (customer : Int) (route : Nat) (wh : Int) :
    Int :=
  I.cost (s.get_prev_vertex route wh) customer + I.cost customer wh -
    I.cost (s.get_prev_vertex route wh) wh

/-- The route `route` serves a neighbour of `customer`. -/
def Near (nb : Int → List Int) (s : Solution) (customer : Int) (route : Nat) : Prop :=
  ∃ n ∈ (nb customer).tail, n ≠ 0 ∧ s.is_customer_in_solution n = true ∧
    s.get_route_index n = route

/-- A capacity-admissible candidate position for `customer`: before the vertex `wh` (a
customer of the route, or the depot for the end of the route) of a route that serves a
neighbour of `customer` and has room for its demand. -/
def Candidate (I : Instance) (nb : Int → List Int) (s : Solution) (customer : Int) (route : Nat)
    (wh : Int) : Prop :=
  Near nb s customer route ∧
  s.get_route_load route + I.demand customer ≤ I.vehicle_capacity ∧
  (wh = 0 ∨ s.get_route_index wh = route)

/-- The position `(route, wh)` is a candidate of minimum insertion cost. -/
def Cheapest (I : Instance) (nb : Int → List Int) (s : Solution) (customer : Int) (route : Nat)
    (wh : Int) : Prop :=
  Candidate I nb s customer route wh ∧
  ∀ r w, Candidate I nb s customer r w →
    insertion_cost I s customer route wh ≤ insertion_cost I s customer r w

/-- The outcome of the recreate step for `customer`: it is inserted at a candidate position
of minimum insertion cost, unless there is no candidate position or twice the cost between
the customer and the depot is below the minimum; then it gets a route of its own. -/
def Placed (I : Instance) (nb : Int → List Int) (fuel : Nat) (s : Solution)
    (routes : SparseIntSet) (customer : Int) : Prop :=
  (∃ route wh, Cheapest I nb s customer route wh ∧
    ¬ (2 * I.cost customer 0 < insertion_cost I s customer route wh) ∧
    (recreate_step I nb fuel s routes customer).map Prod.fst =
      some (Solution.insert_vertex_before I s true route wh customer)) ∨
  (((∀ r w, ¬ Candidate I nb s customer r w) ∨
      ∃ route wh, Cheapest I nb s customer route wh ∧
        2 * I.cost customer 0 < insertion_cost I s customer route wh) ∧
    (recreate_step I nb fuel s routes customer).map Prod.fst =
      some (Solution.build_one_customer_route I s true customer).2)

/-- The variables `best_route`, `best_where`, `best_cost` after the positions `Seen` have
been tried: nothing was found, or the best position is one of least cost among them. -/
def BestOK (cost : Nat → Int → Int) (Seen : Nat → Int → Prop) (b : Best) : Prop :=
  (b.cost = none → b.route = 0 ∧ ∀ r w, ¬ Seen r w) ∧
  (∀ c, b.cost = some c → Seen b.route b.wh ∧ cost b.route b.wh = c ∧
    ∀ r w, Seen r w → c ≤ cost r w)

/-- A solution reached by the mutating operations in which every present route is a cycle
through the depot with at least one customer and respects the capacity. -/
structure Sound (I : Instance) (fuel : Nat) (s : Solution) (A : Nat → List Int) : Prop where
  mutated : Mutated I fuel s A
  depot : ∀ r, A r ≠ [] → (0 : Int) ∈ A r
  full : ∀ r, A r ≠ [] → ∃ c ∈ A r, c ≠ 0
  cap : ∀ r, loadOf I (A r) ≤ I.vehicle_capacity

end RuinAndRecreate

/-- Neighbour lists in which every vertex has no neighbour but itself. -/
def soloNb : Int → List Int := fun c => [c]

/-- The solution of `zeroInstance` with the single route `1: depot, 1, 2, 3, depot`. -/
def zeroFull : Solution :=
  Solution.insert_vertex_before zeroInstance
    (Solution.insert_vertex_before zeroInstance zeroOne false 1 0 2) false 1 0 3

/-! ## SmallFlatSet, SmallFlatMap, BitMatrix and the ejection chain

Shallow embedding of `src/base/SmallFlatSet.hpp`, `src/base/SmallFlatMap.hpp`,
`src/base/BitMatrix.hpp` and of the class `EjectionChain<25>` of
`src/localsearch/EjectionChain.hpp`. The buffers of the open-addressing tables are functions
from the slot; `unsigned int` values are naturals below `2 ^ 32`. The relocation nodes are
named by their index in `relocation_nodes`, the move generators by their index in `moves`;
the fields `heap_index` and `delta_sum` of the relocation nodes are the fields `heap_index`
and `delta` of the heap `relo_heap`, the fields `heap_index` and `delta` of the move
generators are those of the heap `moves_heap` (see `MGHeap`). The tolerance is an exact
number, as the arc costs are. -/

/-- Function `next2pow` of both table classes. -/
def next2pow (v : Nat) : Nat :=
  let v0 := v - 1
  let v1 := v0 ||| (v0 >>> 1)
  let v2 := v1 ||| (v1 >>> 2)
  let v3 := v2 ||| (v2 >>> 4)
  let v4 := v3 ||| (v3 >>> 8)
  let v5 := v4 ||| (v4 >>> 16)
  v5 + 1

/-- Conversion of an `int` to `unsigned int`. -/
def to_unsigned (v : Int) : Nat := (v % 4294967296).toNat

/-- The loop of `find`, the same in `SmallFlatSet` and `SmallFlatMap`: from slot `index` on,
cyclically, until the slot holds `v` or is empty; returns the index of that slot, `none` when
the fuel runs out. -/
def probe (keys : Nat → Nat) (emptyValue realSize v : Nat) : Nat → Nat → Option Nat
  | 0, _ => none
  | fuel + 1, index =>
    if keys index ≠ v ∧ keys index ≠ emptyValue then
      probe keys emptyValue realSize v fuel ((index + 1) &&& (realSize - 1))
    else some index

namespace SmallFlatSet

/-- Template argument `emptyValue` of the rows of `BitMatrix`: `static_cast<unsigned>(~0)`. -/
def emptyValue : Nat := 4294967295

/-- Method `find`; returns the index of the slot. The loop is given `realSize` passes. -/
def find (realSize : Nat) (buffer : Nat → Nat) (v : Nat) : Option Nat :=
  probe buffer emptyValue realSize v realSize (v &&& (realSize - 1))

/-- Method `insert`. -/
def insert (realSize : Nat) (buffer : Nat → Nat) (v : Nat) : Option (Nat → Nat) :=
  match find realSize buffer v with
  | none => none
  | some p => if buffer p ≠ emptyValue then some buffer else some (upd buffer p v)

/-- Method `count`, as a truth value. -/
def count (realSize : Nat) (buffer : Nat → Nat) (v : Nat) : Option Bool :=
  match find realSize buffer v with
  | none => none
  | some p => some (decide (buffer p ≠ emptyValue))

/-- Method `clear`. -/
def clear : Nat → Nat := fun _ => emptyValue

end SmallFlatSet

/-- The class `BitMatrix<maxSize>`: `realSize` of its rows and the buffers of the rows. -/
structure BitMatrix where
  realSize : Nat
  data : Nat → Nat → Nat

namespace BitMatrix

/-- Constructor `BitMatrix<maxSize>(rows)`. -/
def create (maxSize : Nat) : BitMatrix :=
  { realSize := next2pow (maxSize * 5 / 4), data := fun _ => SmallFlatSet.clear }

/-- Method `reset`. -/
def reset (m : BitMatrix) (row : Nat) : BitMatrix :=
  { m with data := upd m.data row SmallFlatSet.clear }

/-- Method `set`. -/
def set (m : BitMatrix) (row : Nat) (entry : Int) : Option BitMatrix :=
  match SmallFlatSet.insert m.realSize (m.data row) (to_unsigned entry) with
  | none => none
  | some b => some { m with data := upd m.data row b }

/-- Method `is_set`. -/
def is_set (m : BitMatrix) (row : Nat) (entry : Int) : Option Bool :=
  SmallFlatSet.count m.realSize (m.data row) (to_unsigned entry)

/-- Method `overwrite`. -/
def overwrite (m : BitMatrix) (source_row destination_row : Nat) : BitMatrix :=
  { m with data := upd m.data destination_row (m.data source_row) }

end BitMatrix

namespace SmallFlatMap

/-- Constant `realSize` of `SmallFlatMap<int, int, 0, 25>`. -/
def realSize : Nat := next2pow (25 * 5 / 4)

/-- Method `find`; returns the index of the slot. The keys are route indices, the empty key
is 0. -/
def find (buffer : Nat → Nat × Int) (k : Nat) : Option Nat :=
  probe (fun p => (buffer p).1) 0 realSize k realSize (k &&& (realSize - 1))

/-- Assignment `map[k] = v` through `operator[]`. -/
def assign (buffer : Nat → Nat × Int) (k : Nat) (v : Int) : Option (Nat → Nat × Int) :=
  match find buffer k with
  | none => none
  | some p => some (upd buffer p (k, v))

/-- Read `map[k]` through `operator[]`, which writes the key into the slot; returns the
value and the new buffer. -/
def read (buffer : Nat → Nat × Int) (k : Nat) : Option (Int × (Nat → Nat × Int)) :=
  match find buffer k with
  | none => none
  | some p => some ((buffer p).2, upd buffer p (k, (buffer p).2))

/-- Method `clear`. -/
def clear (buffer : Nat → Nat × Int) : Nat → Nat × Int := fun p => (0, (buffer p).2)

end SmallFlatMap

/-- The members of `EjectionChain<25>` and the fields of the move generators it reads and
writes; the local variable `rni` of `is_feasible` is kept with them. -/
structure EjectionChain where
  forbidden_i : BitMatrix
  forbidden_j : BitMatrix
  move : Nat → Nat
  predecessor : Nat → Int
  modified_routes_loads : Nat → Nat → Nat × Int
  relo_heap : MGHeap
  feasible_rni : Int
  computed_for_ejch : List Nat
  moves_heap : MGHeap
  computed : Nat → Bool
  rni : Nat

namespace EjectionChain

/-- Template argument `max_relocation_nodes`. -/
def max_relocation_nodes : Nat := 25

/-- Constructor, for move generators whose fields `delta` and `heap_index` are those of
`moves_heap`. -/
def create (moves_heap : MGHeap) : EjectionChain :=
  { forbidden_i := BitMatrix.create (2 * max_relocation_nodes + 3)
    forbidden_j := BitMatrix.create (3 * max_relocation_nodes)
    move := fun _ => 0
    predecessor := fun _ => 0
    modified_routes_loads := fun _ _ => (0, 0)
    relo_heap := MGHeap.empty (fun _ => 0)
    feasible_rni := 0
    computed_for_ejch := []
    moves_heap := moves_heap
    computed := fun _ => false
    rni := 0 }

/-- Method `compute_cost(solution, move)`. -/
def compute_cost (I : Instance) (mg : MoveGenerators) (s : Solution) (move : Nat) : Int :=
  let i := (mg.get move).1
  let j := (mg.get move).2
  let iRoute := s.get_route_index_fallback i j
  let jRoute := s.get_route_index_fallback j i
  let iPrev := s.get_prev_vertex iRoute i
  let iNext := s.get_next_vertex iRoute i
  let jPrev := s.get_prev_vertex jRoute j
  if j ≠ iNext then
    -s.get_cost_prev_vertex iRoute i - s.get_cost_prev_vertex iRoute iNext + I.cost iPrev iNext
      - s.get_cost_prev_vertex jRoute j + I.cost jPrev i + mg.get_edge_cost move
  else 0

/-- The two `forbidden_i.set` calls of a node. -/
def forbid_i (f : BitMatrix) (row : Nat) (iPrev jPrev : Int) : Option BitMatrix :=
  match f.set row iPrev with
  | none => none
  | some f1 => f1.set row jPrev

/-- The three `forbidden_j.set` calls of a node. -/
def forbid_j (f : BitMatrix) (row : Nat) (i iNext j : Int) : Option BitMatrix :=
  match f.set row i with
  | none => none
  | some f1 =>
    match f1.set row iNext with
    | none => none
    | some f2 => f2.set row j

/-- The two assignments to the map `modified_routes_loads` of a node. -/
def set_loads (buffer : Nat → Nat × Int) (iRoute : Nat) (iLoad : Int) (jRoute : Nat)
    (jLoad : Int) : Option (Nat → Nat × Int) :=
  match SmallFlatMap.assign buffer iRoute iLoad with
  | none => none
  | some b1 => SmallFlatMap.assign b1 jRoute jLoad

/-- The five `forbidden_i.set` calls of the branch of `is_feasible` taken when the
generating move is feasible by itself. -/
def forbid_all (f : BitMatrix) (iPrev i iNext jPrev j : Int) : Option BitMatrix :=
  match f.set 0 iPrev with
  | none => none
  | some f1 =>
    match f1.set 0 i with
    | none => none
    | some f2 =>
      match f2.set 0 iNext with
      | none => none
      | some f3 =>
        match f3.set 0 jPrev with
        | none => none
        | some f4 => f4.set 0 j

/-- The branch of `is_feasible` taken when the generating move is feasible by itself. -/
def accept_root (st : EjectionChain) (iPrev i iNext jPrev j : Int) : Option EjectionChain :=
  match forbid_all (st.forbidden_i.reset 0) iPrev i iNext jPrev j with
  | none => none
  | some f5 =>
    some { st with feasible_rni := 0, predecessor := upd st.predecessor 0 (-1),
                   forbidden_i := f5, forbidden_j := st.forbidden_j.reset 0 }

/-- The statements of `is_feasible` that set up the root of the relocation tree. -/
def open_root (I : Instance) (s : Solution) (st : EjectionChain) (delta : Int)
    (iRoute jRoute : Nat) (iPrev i iNext jPrev j : Int) : Option EjectionChain :=
  match forbid_i (st.forbidden_i.reset st.rni) st.rni iPrev jPrev with
  | none => none
  | some fi =>
    match forbid_j (st.forbidden_j.reset st.rni) st.rni i iNext j with
    | none => none
    | some fj =>
      match set_loads (SmallFlatMap.clear (st.modified_routes_loads st.rni)) iRoute
          (s.get_route_load iRoute - I.demand i) jRoute (s.get_route_load jRoute + I.demand i) with
      | none => none
      | some b =>
        match ((st.relo_heap.set_delta st.rni delta).reset).insert st.rni with
        | none => none
        | some h =>
          some { st with forbidden_i := fi, forbidden_j := fj,
                         modified_routes_loads := upd st.modified_routes_loads st.rni b,
                         predecessor := upd st.predecessor st.rni (-1),
                         relo_heap := h, rni := st.rni + 1 }

/-- The lambda `jRoute_load` of `is_feasible`. -/
def jRoute_load (s : Solution) (st : EjectionChain) (curr_index jRoute : Nat) : Option Int :=
  match SmallFlatMap.find (st.modified_routes_loads curr_index) jRoute with
  | none => none
  | some p =>
    if (st.modified_routes_loads curr_index p).1 ≠ 0 then
      some (st.modified_routes_loads curr_index p).2
    else some (s.get_route_load jRoute)

/-- The statements of `is_feasible` that create the relocation node `rni` for the move
`move_index` from `i` to before `j`, up to the insertion into the heap. -/
def add_node (st : EjectionChain) (curr_index move_index : Nat) (iRoute : Nat)
    (iRoute_load : Int) (jRoute : Nat) (jLoad : Int) (iDemand : Int)
    (iPrev i iNext jPrev j : Int) : Option EjectionChain :=
  match forbid_i (st.forbidden_i.overwrite curr_index st.rni) st.rni iPrev jPrev with
  | none => none
  | some fi =>
    match forbid_j (st.forbidden_j.overwrite curr_index st.rni) st.rni i iNext j with
    | none => none
    | some fj =>
      match set_loads (st.modified_routes_loads curr_index) iRoute (iRoute_load - iDemand) jRoute
          (jLoad + iDemand) with
      | none => none
      | some b =>
        match (st.relo_heap.set_delta st.rni
            (st.relo_heap.delta curr_index + st.moves_heap.delta move_index)).insert st.rni with
        | none => none
        | some h =>
          some { st with move := upd st.move st.rni move_index,
                         forbidden_i := fi, forbidden_j := fj,
                         modified_routes_loads := upd st.modified_routes_loads st.rni b,
                         predecessor := upd st.predecessor st.rni (curr_index : Int),
                         relo_heap := h }

/-- The block of `is_feasible` that computes the delta of a move generator which is neither
heaped nor computed yet; `c` is the pair of `iCost_computed` and `iCost`. -/
def refresh_delta (I : Instance) (mg : MoveGenerators) (s : Solution) (iRoute : Nat)
    (iPrev i iNext jPrev j : Int) (move_index : Nat) (c : Bool × Int) (st : EjectionChain) :
    EjectionChain × (Bool × Int) :=
  if st.moves_heap.heap_index move_index = -1 ∧ st.computed move_index = false then
    let iCost :=
      if c.1 = false then
        -s.get_cost_prev_customer i - s.get_cost_prev_vertex iRoute iNext + I.cost iPrev iNext
      else c.2
    let correct_delta := iCost - s.get_cost_prev_customer j + I.cost jPrev i +
      mg.get_edge_cost move_index
    ({ st with moves_heap := st.moves_heap.set_delta move_index correct_delta,
               computed := upd st.computed move_index true,
               computed_for_ejch := st.computed_for_ejch ++ [move_index] }, (true, iCost))
  else (st, c)

/-- One pass through the body of the loop over the move generators of `i`; returns the
state, the pair of `iCost_computed` and `iCost`, and whether `goto end` was taken. -/
def try_move (I : Instance) (mg : MoveGenerators) (tolerance : Int) (s : Solution)
    (curr_index iRoute : Nat) (iRoute_load : Int) (i iPrev iNext : Int) (move_index : Nat)
    (c : Bool × Int) (st : EjectionChain) : Option (EjectionChain × (Bool × Int) × Bool) :=
  let j := (mg.get move_index).2
  if j = 0 then some (st, c, false)
  else
    match st.forbidden_j.is_set curr_index j with
    | none => none
    | some true => some (st, c, false)
    | some false =>
      let jRoute := s.get_route_index j
      if jRoute = iRoute then some (st, c, false)
      else
        match jRoute_load s st curr_index jRoute with
        | none => none
        | some jLoad =>
          let jPrev := s.get_prev_vertex jRoute j
          let r := refresh_delta I mg s iRoute iPrev i iNext jPrev j move_index c st
          if r.1.moves_heap.delta move_index + r.1.relo_heap.delta curr_index > -tolerance then
            some (r.1, r.2, false)
          else
            match r.1.add_node curr_index move_index iRoute iRoute_load jRoute jLoad
                (I.demand i) iPrev i iNext jPrev j with
            | none => none
            | some st2 =>
              if jLoad + I.demand i ≤ I.vehicle_capacity then
                some ({ st2 with feasible_rni := (st2.rni : Int) }, r.2, true)
              else
                let st3 := { st2 with rni := st2.rni + 1 }
                some (st3, r.2, decide (st3.rni = max_relocation_nodes))

/-- The loop over the move generators of `i`. -/
def move_loop (I : Instance) (mg : MoveGenerators) (tolerance : Int) (s : Solution)
    (curr_index iRoute : Nat) (iRoute_load : Int) (i iPrev iNext : Int) :
    List Nat → Bool × Int → EjectionChain → Option (EjectionChain × Bool)
  | [], _, st => some (st, false)
  | move_index :: rest, c, st =>
    match try_move I mg tolerance s curr_index iRoute iRoute_load i iPrev iNext move_index c st with
    | none => none
    | some (st2, c2, true) => some (st2, true)
    | some (st2, c2, false) =>
      move_loop I mg tolerance s curr_index iRoute iRoute_load i iPrev iNext rest c2 st2

/-- One pass through the body of the loop over the customers of `iRoute`; returns the state
and whether `goto end` was taken. -/
def try_customer (I : Instance) (mg : MoveGenerators) (tolerance : Int) (s : Solution)
    (curr_index iRoute : Nat) (iRoute_load : Int) (i : Int) (st : EjectionChain) :
    Option (EjectionChain × Bool) :=
  if iRoute_load - I.demand i > I.vehicle_capacity then some (st, false)
  else
    match st.forbidden_i.is_set curr_index i with
    | none => none
    | some true => some (st, false)
    | some false =>
      match st.forbidden_j.is_set curr_index i with
      | none => none
      | some true => some (st, false)
      | some false =>
        move_loop I mg tolerance s curr_index iRoute iRoute_load i (s.get_prev_vertex iRoute i)
          (s.get_next_vertex iRoute i) (mg.get_move_generator_indices_involving_1st i) (false, 0) st

/-- The loop over the customers of `iRoute`, from `i` on. -/
def customer_loop (I : Instance) (mg : MoveGenerators) (tolerance : Int) (s : Solution)
    (curr_index iRoute : Nat) (iRoute_load : Int) :
    Nat → Int → EjectionChain → Option (EjectionChain × Bool)
  | 0, _, _ => none
  | fuel + 1, i, st =>
    if i = 0 then some (st, false)
    else
      match try_customer I mg tolerance s curr_index iRoute iRoute_load i st with
      | none => none
      | some (st2, true) => some (st2, true)
      | some (st2, false) =>
        customer_loop I mg tolerance s curr_index iRoute iRoute_load fuel
          (s.get_next_customer_vertex i) st2

/-- The `while (!relo_heap.empty())` loop of `is_feasible`. -/
def main_loop (I : Instance) (mg : MoveGenerators) (tolerance : Int) (s : Solution)
    (fuel : Nat) : Nat → EjectionChain → Option EjectionChain
  | 0, _ => none
  | n + 1, st =>
    if st.relo_heap.size = 0 then some st
    else
      match st.relo_heap.get with
      | none => none
      | some (curr_index, h) =>
        let st1 := { st with relo_heap := h }
        let iRoute := s.get_route_index (mg.get (st1.move curr_index)).2
        match SmallFlatMap.read (st1.modified_routes_loads curr_index) iRoute with
        | none => none
        | some (iRoute_load, b) =>
          let st2 := { st1 with modified_routes_loads := upd st1.modified_routes_loads curr_index b }
          match customer_loop I mg tolerance s curr_index iRoute iRoute_load fuel
              (s.get_first_customer iRoute) st2 with
          | none => none
          | some (st3, true) => some st3
          | some (st3, false) => main_loop I mg tolerance s fuel n st3

/-- Method `is_feasible(solution, generating_move)`; returns the returned value and the new
state. -/
def is_feasible (I : Instance) (mg : MoveGenerators) (tolerance : Int) (fuel : Nat)
    (s : Solution) (st : EjectionChain) (generating_move : Nat) : Option (Bool × EjectionChain) :=
  let st0 := { st with rni := 0, feasible_rni := -1 }
  let i := (mg.get generating_move).1
  let j := (mg.get generating_move).2
  let iRoute := s.get_route_index_fallback i j
  let jRoute := s.get_route_index_fallback j i
  let iPrev := s.get_prev_vertex iRoute i
  let iNext := s.get_next_vertex iRoute i
  let jPrev := s.get_prev_vertex jRoute j
  let st1 := { st0 with move := upd st0.move st0.rni generating_move }
  if iRoute = jRoute ∨ s.get_route_load jRoute + I.demand i ≤ I.vehicle_capacity then
    match st1.accept_root iPrev i iNext jPrev j with
    | none => none
    | some st2 => some (true, st2)
  else
    match open_root I s st1 (st1.moves_heap.delta generating_move) iRoute jRoute iPrev i iNext
        jPrev j with
    | none => none
    | some st2 =>
      match main_loop I mg tolerance s fuel fuel st2 with
      | none => none
      | some st3 => some (decide (st3.feasible_rni ≠ -1), st3)

/-- One pass through the body of the last loop of `execute`: the relocation of the first
vertex `i` of a move to before its second vertex `j` (the update bits are not part of the
solution). -/
def relocate (I : Instance) (s : Solution) (i j : Int) : Solution :=
  let iRoute := s.get_route_index_fallback i j
  let jRoute := s.get_route_index_fallback j i
  let s1 := (Solution.remove_vertex I s true iRoute i).1
  let s2 := Solution.insert_vertex_before I s1 true jRoute j i
  if s2.is_route_empty iRoute = true then s2.remove_route true iRoute else s2

/-- The loop of `execute` that applies the relocations of the chain, from the node `ptr`
back to the root. -/
def execute_loop (I : Instance) (mg : MoveGenerators) (st : EjectionChain) :
    Nat → Int → Solution → Option Solution
  | 0, _, _ => none
  | fuel + 1, ptr, s =>
    if ptr = -1 then some s
    else
      execute_loop I mg st fuel (st.predecessor ptr.toNat)
        (relocate I s (mg.get (st.move ptr.toNat)).1 (mg.get (st.move ptr.toNat)).2)

/-- Method `execute(solution, generating_move, affected_vertices)`, the solution it leaves
(the set of affected vertices, the update bits and the flags of the move generators are not
part of the solution). -/
def execute (I : Instance) (mg : MoveGenerators) (st : EjectionChain) (fuel : Nat)
    (s : Solution) : Option Solution :=
  execute_loop I mg st fuel st.feasible_rni s

/-- The move generators of the recorded chain, from the node `ptr` back to the root. -/
def chain (st : EjectionChain) : Nat → Int → List Nat
  | 0, _ => []
  | fuel + 1, ptr =>
    if ptr = -1 then [] else st.move ptr.toNat :: chain st fuel (st.predecessor ptr.toNat)

end EjectionChain

/-! ## Invariants of the open-addressing tables -/

/-- The open-addressing table `keys` of `M` slots, with empty value `e`, holds the values of
`S`: every slot is empty or holds a value of `S`, no value is held twice, and every value of
`S` is found from its home slot `v % M` without passing an empty slot. -/
structure TableOK (keys : Nat → Nat) (e M : Nat) (S : Finset Nat) : Prop where
  slots : ∀ p, p < M → keys p = e ∨ keys p ∈ S
  inj : ∀ p q, p < M → q < M → keys p = keys q → keys p ≠ e → p = q
  reach : ∀ v ∈ S, ∃ d, d < M ∧ keys ((v + d) % M) = v ∧ ∀ c, c < d → keys ((v + c) % M) ≠ e
  ne : e ∉ S

/-- Row `row` of the bit matrix holds the vertices of `S`. -/
structure BitMatrix.RowOK (m : BitMatrix) (row : Nat) (S : List Int) : Prop where
  table : TableOK (m.data row) SmallFlatSet.emptyValue m.realSize (S.map to_unsigned).toFinset
  range : ∀ v ∈ S, 0 ≤ v ∧ v < 2147483647

/-- The map `buffer` has the keys `K`, with the values given by `f`. -/
structure SmallFlatMap.MapOK (buffer : Nat → Nat × Int) (K : Finset Nat) (f : Nat → Int) :
    Prop where
  table : TableOK (fun p => (buffer p).1) 0 SmallFlatMap.realSize K
  vals : ∀ p, p < SmallFlatMap.realSize → (buffer p).1 ≠ 0 → (buffer p).2 = f (buffer p).1

/-! ## The relocations of a chain -/

namespace EjectionChain

/-- The relocations of the moves of `l`, applied in turn. -/
def run (I : Instance) (mg : MoveGenerators) : List Nat → Solution → Solution
  | [], s => s
  | m :: rest, s => run I mg rest (relocate I s (mg.get m).1 (mg.get m).2)

/-- The change of the stored cost by the relocation of move `m`, from what solution `s`
stores at its two customers. -/
def bracket (I : Instance) (mg : MoveGenerators) (s : Solution) (m : Nat) : Int :=
  (I.cost (s.customers_list (mg.get m).1).prev (s.customers_list (mg.get m).1).next
    - I.cost (s.customers_list (mg.get m).1).prev (mg.get m).1
    - I.cost (mg.get m).1 (s.customers_list (mg.get m).1).next) +
  (I.cost (s.customers_list (mg.get m).2).prev (mg.get m).1 + I.cost (mg.get m).1 (mg.get m).2
    - (s.customers_list (mg.get m).2).c_prev_curr)

/-- The change of the load of route `r` by the relocation of move `m`. -/
def gain (I : Instance) (mg : MoveGenerators) (s : Solution) (r : Nat) (m : Nat) : Int :=
  (if r = (s.customers_list (mg.get m).2).route_ptr then I.demand (mg.get m).1 else 0) -
  (if r = (s.customers_list (mg.get m).1).route_ptr then I.demand (mg.get m).1 else 0)

/-- Move `m` relocates a customer to before another customer that is not its successor. -/
def Proper (mg : MoveGenerators) (s : Solution) (m : Nat) : Prop :=
  (mg.get m).1 ≠ 0 ∧ (mg.get m).2 ≠ 0 ∧ (mg.get m).1 ≠ (mg.get m).2 ∧
  (mg.get m).2 ≠ (s.customers_list (mg.get m).1).next ∧
  (s.customers_list (mg.get m).2).prev ≠ (mg.get m).1

/-- The relocation of move `a` writes none of the fields that the relocation of move `b`
reads. -/
def Indep (mg : MoveGenerators) (s : Solution) (a b : Nat) : Prop :=
  ((mg.get b).1 ≠ (mg.get a).1 ∧ (mg.get b).1 ≠ (s.customers_list (mg.get a).1).next ∧
    (mg.get b).1 ≠ (mg.get a).2 ∧ (mg.get b).1 ≠ (s.customers_list (mg.get a).1).prev ∧
    (mg.get b).1 ≠ (s.customers_list (mg.get a).2).prev) ∧
  ((mg.get b).2 ≠ (mg.get a).1 ∧ (mg.get b).2 ≠ (s.customers_list (mg.get a).1).next ∧
    (mg.get b).2 ≠ (mg.get a).2)

/-- Solution `t` stores at the two customers of move `m` what solution `s` stores there, as
far as the relocation of `m` reads it. -/
def Kept (mg : MoveGenerators) (s t : Solution) (m : Nat) : Prop :=
  ((t.customers_list (mg.get m).1).prev = (s.customers_list (mg.get m).1).prev ∧
    (t.customers_list (mg.get m).1).next = (s.customers_list (mg.get m).1).next ∧
    (t.customers_list (mg.get m).1).route_ptr = (s.customers_list (mg.get m).1).route_ptr) ∧
  ((t.customers_list (mg.get m).2).prev = (s.customers_list (mg.get m).2).prev ∧
    (t.customers_list (mg.get m).2).c_prev_curr = (s.customers_list (mg.get m).2).c_prev_curr ∧
    (t.customers_list (mg.get m).2).route_ptr = (s.customers_list (mg.get m).2).route_ptr)

end EjectionChain

/-- What the search for a chain reads of a complete solution: every customer is in a route
of the solution, its two links stay in the route and are inverse to each other, the cached
arc costs are the arc costs, the walk from the first customer of its route reaches the depot
after the customers of the route, and no route of the solution is loaded beyond the
capacity. -/
structure Served (I : Instance) (s : Solution) : Prop where
  ptr : ∀ v, 0 < v → v < (I.vertices_num : Int) → (s.customers_list v).route_ptr ≠ 0 ∧
    (s.routes_list (s.customers_list v).route_ptr).in_solution = true
  range : ∀ v, 0 < v → v < (I.vertices_num : Int) →
    (0 ≤ (s.customers_list v).prev ∧ (s.customers_list v).prev < (I.vertices_num : Int) ∧
      (s.customers_list v).prev ≠ v) ∧
    (0 ≤ (s.customers_list v).next ∧ (s.customers_list v).next < (I.vertices_num : Int) ∧
      (s.customers_list v).next ≠ v)
  back : ∀ v, 0 < v → v < (I.vertices_num : Int) → (s.customers_list v).prev ≠ 0 →
    (s.customers_list (s.customers_list v).prev).next = v ∧
    (s.customers_list (s.customers_list v).prev).route_ptr = (s.customers_list v).route_ptr
  forth : ∀ v, 0 < v → v < (I.vertices_num : Int) → (s.customers_list v).next ≠ 0 →
    (s.customers_list (s.customers_list v).next).prev = v ∧
    (s.customers_list (s.customers_list v).next).route_ptr = (s.customers_list v).route_ptr
  cc : ∀ v, 0 < v → v < (I.vertices_num : Int) →
    (s.customers_list v).c_prev_curr = I.cost (s.customers_list v).prev v ∧
    s.get_cost_prev_vertex (s.customers_list v).route_ptr (s.customers_list v).next =
      I.cost v (s.customers_list v).next
  walk : ∀ v, 0 < v → v < (I.vertices_num : Int) → ∃ x t,
    s.get_first_customer (s.customers_list v).route_ptr = x ∧
    NextChain (fun u => (s.customers_list u).next) x t 0 ∧
    (∀ u ∈ x :: t, 0 < u ∧ u < (I.vertices_num : Int) ∧
      (s.customers_list u).route_ptr = (s.customers_list v).route_ptr) ∧
    t.length + 1 < I.vertices_num
  cap : ∀ r, (s.routes_list r).in_solution = true → (s.routes_list r).load ≤ I.vehicle_capacity

/-! ## Invariants of the search for a chain -/

namespace EjectionChain

/-- The vertices that the nodes of a path have put into their row of `forbidden_i`. -/
def forb_i (mg : MoveGenerators) (s : Solution) : List Nat → List Int
  | [] => []
  | m :: rest => (s.customers_list (mg.get m).2).prev :: (s.customers_list (mg.get m).1).prev ::
      forb_i mg s rest

/-- The vertices that the nodes of a path have put into their row of `forbidden_j`. -/
def forb_j (mg : MoveGenerators) (s : Solution) : List Nat → List Int
  | [] => []
  | m :: rest => (mg.get m).2 :: (s.customers_list (mg.get m).1).next :: (mg.get m).1 ::
      forb_j mg s rest

/-- The routes whose load the moves of a path change. -/
def touched (mg : MoveGenerators) (s : Solution) : List Nat → Finset Nat
  | [] => ∅
  | m :: rest => insert (s.customers_list (mg.get m).2).route_ptr
      (insert (s.customers_list (mg.get m).1).route_ptr (touched mg s rest))

/-- The load of route `r` after the moves of a path. -/
def loads_after (I : Instance) (mg : MoveGenerators) (s : Solution) (l : List Nat) (r : Nat) :
    Int :=
  (s.routes_list r).load + (l.map (gain I mg s r)).sum

/-- Move `m` relocates a customer to before a customer of another route. -/
def Inter (I : Instance) (mg : MoveGenerators) (s : Solution) (m : Nat) : Prop :=
  (0 < (mg.get m).1 ∧ (mg.get m).1 < (I.vertices_num : Int)) ∧
  (0 < (mg.get m).2 ∧ (mg.get m).2 < (I.vertices_num : Int)) ∧
  (s.customers_list (mg.get m).1).route_ptr ≠ (s.customers_list (mg.get m).2).route_ptr

/-- Move `a` respects what the node of move `b` has forbidden: its first vertex is in neither
row of `b`, its second vertex is not in the row of `forbidden_j`. -/
def Free (mg : MoveGenerators) (s : Solution) (a b : Nat) : Prop :=
  ((mg.get a).1 ≠ (s.customers_list (mg.get b).2).prev ∧
    (mg.get a).1 ≠ (s.customers_list (mg.get b).1).prev ∧
    (mg.get a).1 ≠ (mg.get b).2 ∧ (mg.get a).1 ≠ (s.customers_list (mg.get b).1).next ∧
    (mg.get a).1 ≠ (mg.get b).1) ∧
  ((mg.get a).2 ≠ (mg.get b).2 ∧ (mg.get a).2 ≠ (s.customers_list (mg.get b).1).next ∧
    (mg.get a).2 ≠ (mg.get b).1)

/-- Relocation node `n` is the end of the path `P n` of moves, listed from `n` back to the
root: the fields of the node are those of its path. -/
structure NodeOK (I : Instance) (mg : MoveGenerators) (tolerance : Int) (s : Solution)
    (st : EjectionChain) (P : Nat → List Nat) (n : Nat) : Prop where
  path : P n = st.move n :: (if st.predecessor n = -1 then [] else P (st.predecessor n).toNat)
  pred : st.predecessor n = -1 ∨ (0 ≤ st.predecessor n ∧ st.predecessor n < (n : Int))
  len : (P n).length ≤ n + 1
  card : (touched mg s (P n)).card ≤ (P n).length + 1
  inside : ∀ m ∈ P n, m < mg.moves.length
  valid : ∀ m ∈ P n, Inter I mg s m
  free : (P n).Pairwise (Free mg s)
  delta : st.relo_heap.delta n = ((P n).map (compute_cost I mg s)).sum
  le : st.relo_heap.delta n ≤ -tolerance
  fi : st.forbidden_i.RowOK n (forb_i mg s (P n))
  fj : st.forbidden_j.RowOK n (forb_j mg s (P n))
  loads : SmallFlatMap.MapOK (st.modified_routes_loads n) (touched mg s (P n))
    (loads_after I mg s (P n))
  capped : ∀ r ∈ touched mg s (P n), r ≠ (s.customers_list (mg.get (st.move n)).2).route_ptr →
    loads_after I mg s (P n) r ≤ I.vehicle_capacity

/-- What is_feasible expects of the members between two calls, and leaves. -/
structure Ready (st : EjectionChain) : Prop where
  linked : st.relo_heap.Linked
  size_i : st.forbidden_i.realSize = 2 ^ 7
  size_j : st.forbidden_j.realSize = 2 ^ 7

/-- Invariant of the loops of `is_feasible`: the nodes below `rni` are the ends of their
paths, the heap holds nodes below `rni` only, no feasible chain has been found, and the
deltas that the search trusts are those of `compute_cost`. -/
structure SearchInv (I : Instance) (mg : MoveGenerators) (tolerance : Int) (s : Solution)
    (st : EjectionChain) (P : Nat → List Nat) : Prop where
  rni_lt : st.rni < 25
  nodes : ∀ n, n < st.rni → NodeOK I mg tolerance s st P n
  heap : st.relo_heap.OK
  out : ∀ n, st.rni ≤ n → st.relo_heap.heap_index n = -1
  infeasible : st.feasible_rni = -1
  exact : ∀ m, (st.moves_heap.heap_index m ≠ -1 ∨ st.computed m = true) →
    st.moves_heap.delta m = compute_cost I mg s m
  size_i : st.forbidden_i.realSize = 2 ^ 7
  size_j : st.forbidden_j.realSize = 2 ^ 7

/-- The search has found a feasible chain: node `rni`, recorded in `feasible_rni`, is the end
of a path after which no route that the path touches is loaded beyond the capacity. -/
structure Found (I : Instance) (mg : MoveGenerators) (tolerance : Int) (s : Solution)
    (st : EjectionChain) (P : Nat → List Nat) : Prop where
  rni_lt : st.rni < 25
  feasible : st.feasible_rni = (st.rni : Int)
  nodes : ∀ n, n ≤ st.rni → NodeOK I mg tolerance s st P n
  capped : ∀ r ∈ touched mg s (P st.rni), loads_after I mg s (P st.rni) r ≤ I.vehicle_capacity
  ready : st.Ready

/-- The search has stopped: with a feasible chain, or without one. -/
def Stopped (I : Instance) (mg : MoveGenerators) (tolerance : Int) (s : Solution)
    (st : EjectionChain) (P : Nat → List Nat) : Prop :=
  Found I mg tolerance s st P ∨ (st.feasible_rni = -1 ∧ st.Ready)

/-- Result `r` of a part of the search started in state `st`: the paths of the nodes that
existed are kept; when the search goes on the invariant holds and the heap has grown by the
new nodes, otherwise the search has stopped. -/
def Step (I : Instance) (mg : MoveGenerators) (tolerance : Int) (s : Solution)
    (st : EjectionChain) (P : Nat → List Nat) (r : EjectionChain × Bool) : Prop :=
  ∃ P2 : Nat → List Nat, (∀ n, n < st.rni → P2 n = P n) ∧ st.rni ≤ r.1.rni ∧
    (r.2 = false → SearchInv I mg tolerance s r.1 P2 ∧
      r.1.relo_heap.size + st.rni = st.relo_heap.size + r.1.rni) ∧
    (r.2 = true → Stopped I mg tolerance s r.1 P2)

end EjectionChain

namespace EjectionChain

/-- What the loops over the customers of the route of a popped node and over their move
generators know of that node: `iRoute` is the route of the second vertex of its move and
`iRoute_load` the load of that route after the moves of its path. -/
structure Ctx (I : Instance) (mg : MoveGenerators) (s : Solution) (P : Nat → List Nat)
    (curr : Nat) (iRoute : Nat) (iRoute_load : Int) : Prop where
  head : ∃ mv rest, P curr = mv :: rest ∧ iRoute = (s.customers_list (mg.get mv).2).route_ptr
  load : iRoute_load = loads_after I mg s (P curr) iRoute

end EjectionChain

/-- What the relocation of a generating move reads of the ends of the route of a customer:
the first and the last customer of the route are customers next to the depot, and a customer
whose predecessor is the depot is the first customer of its route. -/
structure Ends (I : Instance) (s : Solution) : Prop where
  first : ∀ v, 0 < v → v < (I.vertices_num : Int) →
    0 < (s.routes_list (s.customers_list v).route_ptr).first_customer ∧
    (s.routes_list (s.customers_list v).route_ptr).first_customer < (I.vertices_num : Int) ∧
    (s.customers_list (s.routes_list (s.customers_list v).route_ptr).first_customer).prev = 0
  last : ∀ v, 0 < v → v < (I.vertices_num : Int) →
    0 < (s.routes_list (s.customers_list v).route_ptr).last_customer ∧
    (s.routes_list (s.customers_list v).route_ptr).last_customer < (I.vertices_num : Int) ∧
    (s.customers_list (s.routes_list (s.customers_list v).route_ptr).last_customer).next = 0 ∧
    (s.customers_list (s.routes_list (s.customers_list v).route_ptr).last_customer).route_ptr =
      (s.customers_list v).route_ptr
  head : ∀ v, 0 < v → v < (I.vertices_num : Int) → (s.customers_list v).prev = 0 →
    (s.routes_list (s.customers_list v).route_ptr).first_customer = v

/-- The move generators of the chain that `is_feasible` has recorded, from its last node back
to the root. -/
def EjectionChain.recorded (st : EjectionChain) : List Nat :=
  EjectionChain.chain st EjectionChain.max_relocation_nodes st.feasible_rni

/-! ## Demonstration instances for the ejection chain

Routes `depot, 2r+1, 2r+2, depot` for `r` below the number of rungs, and the last route
`depot, 2r+1, depot`; every even customer has the next customer as its only neighbour. -/

/-- Costs of the ladder: 1 to and from the depot, 2 between the two customers of a rung, 1
between the second customer of a rung and the first of the next, 5 otherwise. -/
def ladderCost (i j : Int) : Int :=
  if i = j then 0 else if i = 0 ∨ j = 0 then 1
  else if (min i j) + 1 = max i j then (if (min i j) % 2 = 1 then 2 else 1) else 5

/-- Costs of the instance `brinkI`: as `ladderCost`, but 3 between customers 1 and 2, 1
between customers 3 and 4, and 2 between customers 4 and 5. -/
def brinkCost (i j : Int) : Int :=
  if i = j then 0 else if i = 0 ∨ j = 0 then 1
  else if min i j = 1 ∧ max i j = 2 then 3
  else if min i j = 2 ∧ max i j = 3 then 1
  else if min i j = 3 ∧ max i j = 4 then 1
  else if min i j = 4 ∧ max i j = 5 then 2 else 5

/-- The ladder of 25 rungs: 51 customers of demand 1, capacity 2. -/
def ladderI : Instance := ⟨52, ladderCost, fun v => if v = 0 then 0 else 1, 2⟩

/-- Two rungs with the costs `brinkCost`: 5 customers of demand 1, capacity 2. -/
def brinkI : Instance := ⟨6, brinkCost, fun v => if v = 0 then 0 else 1, 2⟩

/-- One rung with a customer of negative demand: demands 3, -1 and 2, capacity 2. -/
def debtI : Instance :=
  ⟨4, ladderCost, fun v => if v = 1 then 3 else if v = 2 then -1 else if v = 3 then 2 else 0, 2⟩

/-- The neighbour lists of the ladder. -/
def ladderNb : Int → List Int := fun v =>
  if v = 0 then [0, 1] else if v % 2 = 0 then [v, v + 1] else [v, 0]

/-- The solution with the routes of the first `r` rungs. -/
def rungBuild (I : Instance) : Nat → Solution
  | 0 => Solution.fresh I 5
  | r + 1 =>
    let b := Solution.build_one_customer_route I (rungBuild I r) false (2 * r + 1 : Nat)
    Solution.insert_vertex_before I b.2 false b.1 0 (2 * r + 2 : Nat)

/-- The solution with the routes of `r` rungs and the route of customer `2 * r + 1`. -/
def rungS (I : Instance) (r : Nat) : Solution :=
  (Solution.build_one_customer_route I (rungBuild I r) false (2 * r + 1 : Nat)).2

/-- The move generators of the ladder, all active. -/
def rungMG (I : Instance) : MoveGenerators :=
  (MoveGenerators.create I ladderNb 1).set_active_percentage (fun _ => 1)
    ((List.range I.vertices_num).map (fun n => (n : Int)))

/-- The index of the generating move, from customer 2 to customer 3. -/
def rungG (I : Instance) : Nat := (rungMG I).moves.indexOf ((2 : Int), (3 : Int))

/-- The state of the operator between two calls, with the generating move in the heap of
the move generators, its delta being `delta`. -/
def rungSt (I : Instance) (delta : Int) : EjectionChain :=
  EjectionChain.create
    ((((MGHeap.empty (fun _ => 0)).set_delta (rungG I) delta).insert (rungG I)).getD
      (MGHeap.empty (fun _ => 0)))

/-- Move generators with the single pair of customers 1 and 2 of `lineInstance`, none of
them active. -/
def pairMG : MoveGenerators :=
  { MoveGenerators.init lineInstance 1 with moves := [(1, 2), (2, 1)], edge_costs := [1] }

/-- The heap of move generators that holds the move generator 0, with delta -4. -/
def pairHeap : MGHeap :=
  { heap := fun _ => 0, size := 1, delta := fun m => if m = 0 then -4 else 0,
    heap_index := fun m => if m = 0 then 0 else -1 }

/-! ## Copies of a SparseIntSet

The copy constructor and the copy assignment of `src/base/SparseIntSet.hpp` copy the member
`flags` and nothing else: the copy constructor leaves `elements` default-constructed, the
assignment leaves the `elements` of the target as they are. -/

namespace SparseIntSet

/-- Method `size`. -/
def size (s : SparseIntSet) : Nat := s.elements.length

/-- Copy constructor `SparseIntSet(const SparseIntSet& other)`. -/
def copy (other : SparseIntSet) : SparseIntSet := { flags := other.flags, elements := [] }

/-- Copy assignment `operator=(const SparseIntSet& other)`, applied to `self`. -/
def assign (self other : SparseIntSet) : SparseIntSet :=
  { flags := other.flags, elements := self.elements }

end SparseIntSet

/-! ## CircleSector

Shallow embedding of `src/Program/CircleSector.h`. The operator `%` of C++ on `int` is
`Int.tmod` (truncation towards zero). -/

/-- The struct `CircleSector`; the member `end` is called `end_` here. -/
structure CircleSector where
  start : Int
  end_ : Int

namespace CircleSector

/-- Static method `positive_mod`. -/
def positive_mod (i : Int) : Int := Int.tmod (Int.tmod i 65536 + 65536) 65536

/-- Method `isEnclosed`. -/
def isEnclosed (s : CircleSector) (point : Int) : Bool :=
  decide (positive_mod (point - s.start) ≤ positive_mod (s.end_ - s.start))

/-- Static method `overlap`. -/
def overlap (sector1 sector2 : CircleSector) : Bool :=
  decide (positive_mod (sector2.start - sector1.start) ≤
      positive_mod (sector1.end_ - sector1.start)) ||
    decide (positive_mod (sector1.start - sector2.start) ≤
      positive_mod (sector2.end_ - sector2.start))

end CircleSector
/-! ## Order crossover

Shallow embedding of `Genetic::crossoverOX` (`src/Program/Genetic.cpp`), up to the call of
the Split algorithm, which does not write `chromT`. The vectors `chromT` and `freqClient`
are total functions; the two random positions are parameters. -/

namespace Genetic

/-- The loop `while (j % nbClients != (end + 1) % nbClients)` that copies from parent 1;
returns `result.chromT`, `freqClient` and `j`. -/
def copy_loop (nbClients : Nat) (parent1 : Nat → Int) (end_ : Nat) :
    Nat → Nat → (Nat → Int) → (Int → Bool) → Option ((Nat → Int) × (Int → Bool) × Nat)
  | 0, _, _, _ => none
  | fuel + 1, j, result, freqClient =>
    if j % nbClients ≠ (end_ + 1) % nbClients then
      let result2 := upd result (j % nbClients) (parent1 (j % nbClients))
      copy_loop nbClients parent1 end_ fuel (j + 1) result2
        (upd freqClient (result2 (j % nbClients)) true)
    else some (result, freqClient, j)

/-- One pass through the loop that fills the remaining positions from parent 2. -/
def fill_step (nbClients : Nat) (parent2 : Nat → Int) (end_ : Nat) (freqClient : Int → Bool)
    (acc : (Nat → Int) × Nat) (i : Nat) : (Nat → Int) × Nat :=
  if freqClient (parent2 ((end_ + i) % nbClients)) = false then
    (upd acc.1 (acc.2 % nbClients) (parent2 ((end_ + i) % nbClients)), acc.2 + 1)
  else acc

/-- Method `crossoverOX` with the random positions `start` and `end`: the vector
`result.chromT` that it leaves. -/
def crossoverOX (nbClients : Nat) (result parent1 parent2 : Nat → Int) (start end_ : Nat)
    (fuel : Nat) : Option (Nat → Int) :=
  match copy_loop nbClients parent1 end_ fuel start result (fun _ => false) with
  | none => none
  | some (result2, freqClient, j) =>
    some (((List.range nbClients).map (fun i => i + 1)).foldl
      (fill_step nbClients parent2 end_ freqClient) (result2, j)).1

end Genetic
/-- The first `n` entries of `chromT` are a permutation of the customers `1 .. n`. -/
def Genetic.IsTour (n : Nat) (chromT : Nat → Int) : Prop :=
  ((List.range n).map chromT).Perm ((List.range n).map (fun (i : Nat) => (i : Int) + 1))

instance Genetic.IsTour.decidable (n : Nat) (chromT : Nat → Int) :
    Decidable (Genetic.IsTour n chromT) := by
  unfold Genetic.IsTour
  infer_instance
/-! ## CommonOperator

Shallow embedding of the class template `CommonOperator<T, handle_partial_solutions>` of
`src/localsearch/AbstractOperator.hpp`. A move generator is passed by its index in `moves`;
its `delta` and `heap_index` are those of the heap `MGHeap`, which all operators share. The
methods that the operator `T` provides are the fields of `AbstractOperator`; the caches
`Cache12`, `Cache1` and `Cache2` of `T` are the types `K12`, `K1` and `K2`. The state carries
two logs that the source does not have: the moves whose delta the initialization has
computed and the moves it has inserted into the heap, in the order of the calls. -/

/-- Static method `MoveGenerators::get_base_move_generator_index`: `index & ~1`, the index
with its lowest bit cleared. -/
def MoveGenerators.get_base_move_generator_index (index : Nat) : Nat := index - index % 2

/-- Method `MoveGenerators::get_move_generator_indices_involving_2nd`: the view of the
active list of `vertex` through `get_twin_move_generator_index`. -/
def MoveGenerators.get_move_generator_indices_involving_2nd (mg : MoveGenerators)
    (vertex : Int) : List Nat :=
  (mg.active_move_indices_involving_1st vertex).map
    MoveGenerators.get_twin_move_generator_index

/-- Method `Solution::is_vertex_in_solution`. -/
def Solution.is_vertex_in_solution (s : Solution) (vertex : Int) : Bool :=
  decide (vertex = 0) || s.is_customer_in_solution vertex

/-- Macro `UPDATE_BITS_FIRST`. -/
def UPDATE_BITS_FIRST : Nat := 0

/-- Macro `UPDATE_BITS_SECOND`. -/
def UPDATE_BITS_SECOND : Nat := 1

/-- Method `Flat2DVector<bool>::at(i, j, value)` on the update bits. -/
def set_update_bit (bits : Int → Nat → Bool) (i : Int) (j : Nat) (value : Bool) :
    Int → Nat → Bool :=
  upd bits i (upd (bits i) j value)

/-- The methods of a local search operator `T` that `CommonOperator<T>` calls. The four
instances of the template `compute_cost(move, i, j)` that it uses are four fields, named by
the caches they take. -/
structure AbstractOperator (K12 K1 K2 : Type) where
  is_symmetric : Bool
  pre_processing : Solution → Solution
  compute_cost : Solution → Nat → Int
  is_feasible : Solution → Nat → Bool
  execute : Solution → Nat → SparseIntSet → (Int → Nat → Bool) →
    Solution × SparseIntSet × (Int → Nat → Bool)
  post_processing : Solution → Solution
  prepare_cache12 : Solution → Int → K12
  prepare_cache12_backup : Solution → Int → Int → K12
  prepare_cache1 : Solution → Int → K1
  prepare_cache1_backup : Solution → Int → Int → K1
  prepare_cache2 : Solution → Int → K2
  prepare_cache2_backup : Solution → Int → Int → K2
  compute_cost_pair : Nat → K12 → K12 → Int × Int
  compute_cost_12_12 : Nat → K12 → K12 → Int
  compute_cost_12_2 : Nat → K12 → K2 → Int
  compute_cost_1_12 : Nat → K1 → K12 → Int
  compute_cost_1_2 : Nat → K1 → K2 → Int

/-- The data that a local search cycle of `CommonOperator` reads and writes besides the
solution: the heap of the move generators with their deltas, the vertex timestamps and the
timestamp generator of `MoveGenerators`, the update bits, the set `affected_vertices`, and
the two logs of the initialization. -/
structure CommonOperator where
  heap : MGHeap
  vertex_timestamp : Int → Nat
  timegen : Nat
  update_bits : Int → Nat → Bool
  affected_vertices : SparseIntSet
  evaluated : List Nat
  inserted : List Nat

namespace CommonOperator

/-- Assignment `vtimestamp[i] = currenttime`. -/
def stamp (st : CommonOperator) (i : Int) (currenttime : Nat) : CommonOperator :=
  { st with vertex_timestamp := upd st.vertex_timestamp i currenttime }

/-- Statement `timegen.increment()`. -/
def increment (st : CommonOperator) : CommonOperator := { st with timegen := st.timegen + 1 }

/-- The statements `move.set_delta(delta); move.set_heap_index(unheaped);
if (move.get_delta() < -tolerance) heap.insert(&move)` of the initialization. -/
def init_move (tolerance : Int) (st : CommonOperator) (move : Nat) (delta : Int) :
    Option CommonOperator :=
  let h1 := (st.heap.set_delta move delta).set_idx move (-1)
  if h1.delta move < -tolerance then
    (h1.insert move).map (fun h2 =>
      { st with heap := h2, evaluated := st.evaluated ++ [move],
                inserted := st.inserted ++ [move] })
  else some { st with heap := h1, evaluated := st.evaluated ++ [move] }

/-- The lambda `heap_insert` of `symmetric_update` and of `asymmetric_update`, on the
heap. -/
def heap_insert_heap (tolerance : Int) (h : MGHeap) (move : Nat) (delta : Int) :
    Option MGHeap :=
  if delta > -tolerance then
    if h.heap_index move ≠ -1 then
      (h.remove (h.heap_index move).toNat).map (fun h2 => h2.set_delta move delta)
    else some (h.set_delta move delta)
  else
    if h.heap_index move = -1 then (h.set_delta move delta).insert move
    else h.change_value (h.heap_index move).toNat delta

/-- The lambda `heap_insert`, on the state. -/
def heap_insert (tolerance : Int) (st : CommonOperator) (move : Nat) (delta : Int) :
    Option CommonOperator :=
  (heap_insert_heap tolerance st.heap move delta).map (fun h2 => { st with heap := h2 })

section Phases

variable {K12 K1 K2 : Type} (T : AbstractOperator K12 K1 K2) (mg : MoveGenerators)
  (tolerance : Int) (handle_partial_solutions : Bool) (s : Solution) (currenttime : Nat)

/-- Body of the inner loop of `symmetric_init` for the vertex `i` of the SVC, a
customer. -/
def symmetric_init_step (i : Int) (icache : K12) (st : CommonOperator)
    (move_i1st_index : Nat) : Option CommonOperator :=
  let j := (mg.get move_i1st_index).2
  if handle_partial_solutions && !s.is_vertex_in_solution j then some st
  else if st.vertex_timestamp j = currenttime then some st
  else
    let move_index := MoveGenerators.get_base_move_generator_index move_i1st_index
    let jcache := if j = 0 then T.prepare_cache12_backup s j i else T.prepare_cache12 s j
    let delta := T.compute_cost_12_12 move_index icache jcache
    init_move tolerance st move_index delta

/-- Body of the loop of `symmetric_init` for the depot `i`. -/
def symmetric_init_depot_step (i : Int) (st : CommonOperator) (move_i1st_index : Nat) :
    Option CommonOperator :=
  let j := (mg.get move_i1st_index).2
  if handle_partial_solutions && !s.is_vertex_in_solution j then some st
  else if st.vertex_timestamp j = currenttime then some st
  else
    let move_index := MoveGenerators.get_base_move_generator_index move_i1st_index
    let icache := T.prepare_cache12_backup s i j
    let jcache := T.prepare_cache12 s j
    let delta := T.compute_cost_12_12 move_index icache jcache
    init_move tolerance st move_index delta

/-- Body of the loop of `symmetric_init` over the SVC; the flag `depot` is the second
component. -/
def symmetric_init_vertex (acc : CommonOperator × Bool) (i : Int) :
    Option (CommonOperator × Bool) :=
  if handle_partial_solutions && !s.is_vertex_in_solution i then some acc
  else if i = 0 then some (acc.1, true)
  else
    let icache := T.prepare_cache12 s i
    ((mg.get_move_generator_indices_involving_1st i).foldlM
      (symmetric_init_step T mg tolerance handle_partial_solutions s currenttime i icache)
      acc.1).map (fun st2 => (st2.stamp i currenttime, acc.2))

/-- Method `symmetric_init`. The loop over the SVC runs over the list that
`LRUCache.iterate` returns with the given fuel. -/
def symmetric_init (fuel : Nat) (st : CommonOperator) : Option CommonOperator :=
  let currenttime := st.timegen + 1
  match s.cache.iterate fuel s.get_svc_begin with
  | none => none
  | some svc =>
    match svc.foldlM
        (symmetric_init_vertex T mg tolerance handle_partial_solutions s currenttime)
        (st, false) with
    | none => none
    | some (st1, depot) =>
      if depot then
        ((mg.get_move_generator_indices_involving_1st 0).foldlM
          (symmetric_init_depot_step T mg tolerance handle_partial_solutions s currenttime 0)
          st1).map (fun st2 => (st2.stamp 0 currenttime).increment)
      else some st1.increment

/-- The statements of `asymmetric_init` that follow the computation of the caches of a move
and of its twin. -/
def init_pair (st : CommonOperator) (move_index : Nat) (d : Int × Int) :
    Option CommonOperator :=
  (init_move tolerance st move_index d.1).bind (fun st1 =>
    init_move tolerance st1 (MoveGenerators.get_twin_move_generator_index move_index) d.2)

/-- Body of the inner loop of `asymmetric_init` for the vertex `i` of the SVC, a
customer. -/
def asymmetric_init_step (i : Int) (icache : K12) (st : CommonOperator) (move_index : Nat) :
    Option CommonOperator :=
  let j := (mg.get move_index).2
  if handle_partial_solutions && !s.is_vertex_in_solution j then some st
  else if st.vertex_timestamp j = currenttime then some st
  else
    let jcache := if j = 0 then T.prepare_cache12_backup s j i else T.prepare_cache12 s j
    init_pair tolerance st move_index (T.compute_cost_pair move_index icache jcache)

/-- Body of the loop of `asymmetric_init` for the depot `i`. -/
def asymmetric_init_depot_step (i : Int) (st : CommonOperator) (move_index : Nat) :
    Option CommonOperator :=
  let j := (mg.get move_index).2
  if handle_partial_solutions && !s.is_vertex_in_solution j then some st
  else if st.vertex_timestamp j = currenttime then some st
  else
    let icache := T.prepare_cache12_backup s i j
    let jcache := T.prepare_cache12 s j
    init_pair tolerance st move_index (T.compute_cost_pair move_index icache jcache)

/-- Body of the loop of `asymmetric_init` over the SVC; the flag `depot` is the second
component. -/
def asymmetric_init_vertex (acc : CommonOperator × Bool) (i : Int) :
    Option (CommonOperator × Bool) :=
  if handle_partial_solutions && !s.is_vertex_in_solution i then some acc
  else if i = 0 then some (acc.1, true)
  else
    let icache := T.prepare_cache12 s i
    ((mg.get_move_generator_indices_involving_1st i).foldlM
      (asymmetric_init_step T mg tolerance handle_partial_solutions s currenttime i icache)
      acc.1).map (fun st2 => (st2.stamp i currenttime, acc.2))

/-- Method `asymmetric_init`. The loop over the SVC runs over the list that
`LRUCache.iterate` returns with the given fuel. -/
def asymmetric_init (fuel : Nat) (st : CommonOperator) : Option CommonOperator :=
  let currenttime := st.timegen + 1
  match s.cache.iterate fuel s.get_svc_begin with
  | none => none
  | some svc =>
    match svc.foldlM
        (asymmetric_init_vertex T mg tolerance handle_partial_solutions s currenttime)
        (st, false) with
    | none => none
    | some (st1, depot) =>
      if depot then
        ((mg.get_move_generator_indices_involving_1st 0).foldlM
          (asymmetric_init_depot_step T mg tolerance handle_partial_solutions s currenttime 0)
          st1).map (fun st2 => (st2.stamp 0 currenttime).increment)
      else some st1.increment

/-- Method `initialize_descriptors`. -/
def initialize_descriptors (fuel : Nat) (st : CommonOperator) : Option CommonOperator :=
  if T.is_symmetric then
    symmetric_init T mg tolerance handle_partial_solutions s fuel st
  else asymmetric_init T mg tolerance handle_partial_solutions s fuel st

/-- Body of the inner loop of `symmetric_update` for the affected vertex `i`, a
customer. -/
def symmetric_update_step (i : Int) (icache : K12) (st : CommonOperator)
    (move_i1st_index : Nat) : Option CommonOperator :=
  let j := (mg.get move_i1st_index).2
  if handle_partial_solutions && !s.is_vertex_in_solution j then some st
  else if st.vertex_timestamp j = currenttime then some st
  else
    let move_index := MoveGenerators.get_base_move_generator_index move_i1st_index
    let jcache := if j = 0 then T.prepare_cache12_backup s j i else T.prepare_cache12 s j
    heap_insert tolerance st move_index (T.compute_cost_12_12 move_index icache jcache)

/-- Body of the loop of `symmetric_update` for the depot `i`. -/
def symmetric_update_depot_step (i : Int) (st : CommonOperator) (move_i1st_index : Nat) :
    Option CommonOperator :=
  let j := (mg.get move_i1st_index).2
  if handle_partial_solutions && !s.is_vertex_in_solution j then some st
  else if st.vertex_timestamp j = currenttime then some st
  else
    let move_index := MoveGenerators.get_base_move_generator_index move_i1st_index
    let icache := T.prepare_cache12_backup s i j
    let jcache := T.prepare_cache12 s j
    heap_insert tolerance st move_index (T.compute_cost_12_12 move_index icache jcache)

/-- Body of the loop of `symmetric_update` over the affected vertices, which does not
stamp the customers. -/
def symmetric_update_vertex (acc : CommonOperator × Bool) (i : Int) :
    Option (CommonOperator × Bool) :=
  if handle_partial_solutions && !s.is_vertex_in_solution i then some acc
  else if i = 0 then some (acc.1, true)
  else
    let icache := T.prepare_cache12 s i
    ((mg.get_move_generator_indices_involving_1st i).foldlM
      (symmetric_update_step T mg tolerance handle_partial_solutions s currenttime i icache)
      acc.1).map (fun st2 => (st2, acc.2))

/-- Method `symmetric_update`. -/
def symmetric_update (st : CommonOperator) : Option CommonOperator :=
  let currenttime := st.timegen + 1
  match st.affected_vertices.get_elements.foldlM
      (symmetric_update_vertex T mg tolerance handle_partial_solutions s currenttime)
      (st, false) with
  | none => none
  | some (st1, depot) =>
    if depot then
      ((mg.get_move_generator_indices_involving_1st 0).foldlM
        (symmetric_update_depot_step T mg tolerance handle_partial_solutions s currenttime 0)
        st1).map (fun st2 => (st2.stamp 0 currenttime).increment)
    else some st1.increment

/-- Body of the loop of `asymmetric_update` for a customer `i` with both update bits. -/
def update_both_step (i : Int) (icache : K12) (st : CommonOperator) (move_index : Nat) :
    Option CommonOperator :=
  let j := (mg.get move_index).2
  if handle_partial_solutions && !s.is_vertex_in_solution j then some st
  else if st.vertex_timestamp j = currenttime then
    let jupji := st.update_bits j UPDATE_BITS_FIRST
    let jupij := st.update_bits j UPDATE_BITS_SECOND
    if jupji && jupij then some st
    else if jupji then
      let jcache := if j = 0 then T.prepare_cache2_backup s j i else T.prepare_cache2 s j
      heap_insert tolerance st move_index (T.compute_cost_12_2 move_index icache jcache)
    else if jupij then
      let jcache := if j = 0 then T.prepare_cache1_backup s j i else T.prepare_cache1 s j
      let twin_move_index := MoveGenerators.get_twin_move_generator_index move_index
      heap_insert tolerance st twin_move_index
        (T.compute_cost_1_12 twin_move_index jcache icache)
    else some st
  else
    let jcache := if j = 0 then T.prepare_cache12_backup s j i else T.prepare_cache12 s j
    let twin_move_index := MoveGenerators.get_twin_move_generator_index move_index
    let d := T.compute_cost_pair twin_move_index icache jcache
    (heap_insert tolerance st move_index d.1).bind (fun st1 =>
      heap_insert tolerance st1 twin_move_index d.2)

/-- Body of the loop of `asymmetric_update` for a customer `i` with the first update bit
only. -/
def update_first_step (i : Int) (icache : K1) (st : CommonOperator) (move_index : Nat) :
    Option CommonOperator :=
  let j := (mg.get move_index).2
  if handle_partial_solutions && !s.is_vertex_in_solution j then some st
  else if st.vertex_timestamp j ≠ currenttime ∨
      (st.vertex_timestamp j = currenttime ∧ st.update_bits j UPDATE_BITS_SECOND = false) then
    let jcache := if j = 0 then T.prepare_cache2_backup s j i else T.prepare_cache2 s j
    heap_insert tolerance st move_index (T.compute_cost_1_2 move_index icache jcache)
  else some st

/-- Body of the loop of `asymmetric_update` for a customer `i` with the second update bit
only. -/
def update_second_step (i : Int) (icache : K2) (st : CommonOperator) (move_index : Nat) :
    Option CommonOperator :=
  let j := (mg.get move_index).1
  if handle_partial_solutions && !s.is_vertex_in_solution j then some st
  else if st.vertex_timestamp j ≠ currenttime ∨
      (st.vertex_timestamp j = currenttime ∧ st.update_bits j UPDATE_BITS_FIRST = false) then
    let jcache := if j = 0 then T.prepare_cache1_backup s j i else T.prepare_cache1 s j
    heap_insert tolerance st move_index (T.compute_cost_1_2 move_index jcache icache)
  else some st

/-- Body of the loop of `asymmetric_update` over the affected vertices; the flag `depot` is
the second component. -/
def asymmetric_update_vertex (acc : CommonOperator × Bool) (i : Int) :
    Option (CommonOperator × Bool) :=
  if handle_partial_solutions && !s.is_vertex_in_solution i then some acc
  else if i = 0 then some (acc.1, true)
  else
    let iupij := acc.1.update_bits i UPDATE_BITS_FIRST
    let iupji := acc.1.update_bits i UPDATE_BITS_SECOND
    let r :=
      if iupij && iupji then
        (mg.get_move_generator_indices_involving_1st i).foldlM
          (update_both_step T mg tolerance handle_partial_solutions s currenttime i
            (T.prepare_cache12 s i)) acc.1
      else if iupij then
        (mg.get_move_generator_indices_involving_1st i).foldlM
          (update_first_step T mg tolerance handle_partial_solutions s currenttime i
            (T.prepare_cache1 s i)) acc.1
      else if iupji then
        (mg.get_move_generator_indices_involving_2nd i).foldlM
          (update_second_step T mg tolerance handle_partial_solutions s currenttime i
            (T.prepare_cache2 s i)) acc.1
      else some acc.1
    r.map (fun st2 => (st2.stamp i currenttime, acc.2))

/-- Body of the loop of `asymmetric_update` for the depot `i` with both update bits. -/
def update_both_depot_step (i : Int) (st : CommonOperator) (move_index : Nat) :
    Option CommonOperator :=
  let j := (mg.get move_index).2
  if handle_partial_solutions && !s.is_vertex_in_solution j then some st
  else if st.vertex_timestamp j = currenttime then
    let jupji := st.update_bits j UPDATE_BITS_FIRST
    let jupij := st.update_bits j UPDATE_BITS_SECOND
    if jupji && jupij then some st
    else if jupji then
      let icache := T.prepare_cache1_backup s i j
      let jcache := T.prepare_cache2 s j
      heap_insert tolerance st move_index (T.compute_cost_1_2 move_index icache jcache)
    else if jupij then
      let twin_move_index := MoveGenerators.get_twin_move_generator_index move_index
      let icache := T.prepare_cache2_backup s i j
      let jcache := T.prepare_cache1 s j
      heap_insert tolerance st twin_move_index
        (T.compute_cost_1_2 twin_move_index jcache icache)
    else some st
  else
    let icache := T.prepare_cache12_backup s i j
    let jcache := T.prepare_cache12 s j
    let d := T.compute_cost_pair move_index icache jcache
    (heap_insert tolerance st move_index d.1).bind (fun st1 =>
      heap_insert tolerance st1 (MoveGenerators.get_twin_move_generator_index move_index) d.2)

/-- Body of the loop of `asymmetric_update` for the depot `i` with the first update bit
only. -/
def update_first_depot_step (i : Int) (st : CommonOperator) (move_index : Nat) :
    Option CommonOperator :=
  let j := (mg.get move_index).2
  if handle_partial_solutions && !s.is_vertex_in_solution j then some st
  else if st.vertex_timestamp j ≠ currenttime ∨
      (st.vertex_timestamp j = currenttime ∧ st.update_bits j UPDATE_BITS_SECOND = false) then
    let icache := T.prepare_cache1_backup s i j
    let jcache := T.prepare_cache2 s j
    heap_insert tolerance st move_index (T.compute_cost_1_2 move_index icache jcache)
  else some st

/-- Body of the loop of `asymmetric_update` for the depot `i` with the second update bit
only. -/
def update_second_depot_step (i : Int) (st : CommonOperator) (move_index : Nat) :
    Option CommonOperator :=
  let j := (mg.get move_index).1
  if handle_partial_solutions && !s.is_vertex_in_solution j then some st
  else if st.vertex_timestamp j ≠ currenttime ∨
      (st.vertex_timestamp j = currenttime ∧ st.update_bits j UPDATE_BITS_FIRST = false) then
    let icache := T.prepare_cache2_backup s i j
    let jcache := T.prepare_cache1 s j
    heap_insert tolerance st move_index (T.compute_cost_1_2 move_index jcache icache)
  else some st

/-- The part of `asymmetric_update` for the depot. -/
def asymmetric_update_depot (st : CommonOperator) : Option CommonOperator :=
  let iupij := st.update_bits 0 UPDATE_BITS_FIRST
  let iupji := st.update_bits 0 UPDATE_BITS_SECOND
  let r :=
    if iupij && iupji then
      (mg.get_move_generator_indices_involving_1st 0).foldlM
        (update_both_depot_step T mg tolerance handle_partial_solutions s currenttime 0) st
    else if iupij then
      (mg.get_move_generator_indices_involving_1st 0).foldlM
        (update_first_depot_step T mg tolerance handle_partial_solutions s currenttime 0) st
    else if iupji then
      (mg.get_move_generator_indices_involving_2nd 0).foldlM
        (update_second_depot_step T mg tolerance handle_partial_solutions s currenttime 0) st
    else some st
  r.map (fun st2 => st2.stamp 0 currenttime)

/-- The last loop of `asymmetric_update`: the update bits of the affected vertices are
reset. -/
def reset_update_bits (st : CommonOperator) : CommonOperator :=
  let bits2 := st.affected_vertices.get_elements.foldl
    (fun bits i => set_update_bit (set_update_bit bits i UPDATE_BITS_FIRST false) i
      UPDATE_BITS_SECOND false) st.update_bits
  { st with update_bits := bits2 }

/-- Method `asymmetric_update`. -/
def asymmetric_update (st : CommonOperator) : Option CommonOperator :=
  let currenttime := st.timegen + 1
  match st.affected_vertices.get_elements.foldlM
      (asymmetric_update_vertex T mg tolerance handle_partial_solutions s currenttime)
      (st, false) with
  | none => none
  | some (st1, depot) =>
    let r :=
      if depot then
        asymmetric_update_depot T mg tolerance handle_partial_solutions s currenttime st1
      else some st1
    r.map (fun st2 => st2.reset_update_bits.increment)

/-- Method `descriptors_update`. -/
def descriptors_update (st : CommonOperator) : Option CommonOperator :=
  if T.is_symmetric then symmetric_update T mg tolerance handle_partial_solutions s st
  else asymmetric_update T mg tolerance handle_partial_solutions s st

end Phases

end CommonOperator

/-- A state of the local search with an empty heap, in which every move generator has the
delta 0 and is unheaped. -/
def idleOperator : CommonOperator :=
  { heap := MGHeap.empty (fun _ => 0)
    vertex_timestamp := fun _ => 0
    timegen := 0
    update_bits := fun _ _ => false
    affected_vertices := SparseIntSet.create
    evaluated := []
    inserted := [] }

/-- What the local search relies on in the registry of the move generators: the twin of a
move is the move with the endpoints exchanged, the endpoints of a move are distinct, and the
active list of a vertex holds distinct moves with this vertex as first endpoint, the twin of
each of which is in the active list of its second endpoint. -/
structure MoveGenerators.Lists (mg : MoveGenerators) : Prop where
  twin_get : ∀ idx, idx < mg.size →
    mg.get (MoveGenerators.get_twin_move_generator_index idx) = ((mg.get idx).2, (mg.get idx).1)
  twin_lt : ∀ idx, idx < mg.size → MoveGenerators.get_twin_move_generator_index idx < mg.size
  ne : ∀ idx, idx < mg.size → (mg.get idx).1 ≠ (mg.get idx).2
  mem : ∀ v idx, idx ∈ mg.active_move_indices_involving_1st v →
    idx < mg.size ∧ (mg.get idx).1 = v
  nodup : ∀ v, (mg.active_move_indices_involving_1st v).Nodup
  sym : ∀ v idx, idx ∈ mg.active_move_indices_involving_1st v →
    MoveGenerators.get_twin_move_generator_index idx ∈
      mg.active_move_indices_involving_1st (mg.get idx).2

/-- Invariant of an initialization phase with the timestamp `ct`, `pre` being the moves of
the active list of the current vertex that the inner loop has visited: the heap is
consistent, no move occurs twice in a log, the moves inserted were evaluated, a move that
was not evaluated is unheaped, and every move evaluated has an endpoint with the timestamp
`ct` or is a visited move of the current vertex or the twin of one; the delta of a move
evaluated has the property `G`, and the delta of a move in the heap is below `-tolerance`. -/
structure CommonOperator.InitInv (mg : MoveGenerators) (G : Nat → Int → Prop)
    (tolerance : Int) (ct : Nat) (st : CommonOperator) (pre : List Nat) : Prop where
  heap_ok : st.heap.OK
  ev_nodup : st.evaluated.Nodup
  ins_nodup : st.inserted.Nodup
  ins_sub : ∀ m ∈ st.inserted, m ∈ st.evaluated
  unheaped : ∀ m, m ∉ st.evaluated → st.heap.heap_index m = -1
  in_range : ∀ m ∈ st.evaluated, m < mg.size
  covered : ∀ m ∈ st.evaluated,
    st.vertex_timestamp (mg.get m).1 = ct ∨ st.vertex_timestamp (mg.get m).2 = ct ∨
    ∃ idx ∈ pre, m = idx ∨ m = MoveGenerators.get_twin_move_generator_index idx
  vals : ∀ m ∈ st.evaluated, G m (st.heap.delta m)
  lows : ∀ m, st.heap.heap_index m ≠ -1 → st.heap.delta m < -tolerance

/-- The fields of the state other than the heap and the logs are the same in `st2` as in
`st`. -/
def CommonOperator.SameFrame (st2 st : CommonOperator) : Prop :=
  st2.vertex_timestamp = st.vertex_timestamp ∧ st2.timegen = st.timegen ∧
  st2.update_bits = st.update_bits ∧ st2.affected_vertices = st.affected_vertices

/-- What the body of an inner loop of an initialization does at a move of the active list
of the current vertex `i`. -/
def CommonOperator.StepOK (mg : MoveGenerators) (G : Nat → Int → Prop) (tolerance : Int)
    (ct : Nat) (i : Int) (step : CommonOperator → Nat → Option CommonOperator) : Prop :=
  ∀ (st : CommonOperator) (pre : List Nat) (idx : Nat),
    CommonOperator.InitInv mg G tolerance ct st pre →
    st.vertex_timestamp i ≠ ct → idx ∈ mg.active_move_indices_involving_1st i → idx ∉ pre →
    (∀ x ∈ pre, x ∈ mg.active_move_indices_involving_1st i) →
    ∃ st2, step st idx = some st2 ∧
      CommonOperator.InitInv mg G tolerance ct st2 (pre ++ [idx]) ∧
      CommonOperator.SameFrame st2 st


/-- Invariant of the loop of an initialization over the SVC, `done` being the vertices
visited: the invariant `InitInv` holds with no current vertex, the vertices that carry the
timestamp `ct` are customers that have been visited, and no timestamp exceeds `ct`. -/
def CommonOperator.OuterInv (mg : MoveGenerators) (G : Nat → Int → Prop) (tolerance : Int)
    (ct : Nat) (st : CommonOperator) (done : List Int) : Prop :=
  CommonOperator.InitInv mg G tolerance ct st [] ∧
  (∀ v, st.vertex_timestamp v = ct → v ∈ done ∧ v ≠ 0) ∧
  (∀ v, st.vertex_timestamp v ≤ ct)

/-- The timestamp generator, the update bits and the affected vertices are the same in
`st2` as in `st`. -/
def CommonOperator.SameRest (st2 st : CommonOperator) : Prop :=
  st2.timegen = st.timegen ∧ st2.update_bits = st.update_bits ∧
  st2.affected_vertices = st.affected_vertices

/-- The deltas that `asymmetric_init` computes from the caches of the operator `T` for a move
of an active list and for its twin have the property `G`, for the customers and for the
depot. -/
def CommonOperator.PairExact {K12 K1 K2 : Type} (T : AbstractOperator K12 K1 K2)
    (mg : MoveGenerators) (s : Solution) (G : Nat → Int → Prop) : Prop :=
  (∀ (i : Int) (idx : Nat), i ≠ 0 → idx ∈ mg.active_move_indices_involving_1st i →
    G idx (T.compute_cost_pair idx (T.prepare_cache12 s i)
      (if (mg.get idx).2 = 0 then T.prepare_cache12_backup s (mg.get idx).2 i
        else T.prepare_cache12 s (mg.get idx).2)).1 ∧
    G (MoveGenerators.get_twin_move_generator_index idx)
      (T.compute_cost_pair idx (T.prepare_cache12 s i)
        (if (mg.get idx).2 = 0 then T.prepare_cache12_backup s (mg.get idx).2 i
          else T.prepare_cache12 s (mg.get idx).2)).2) ∧
  (∀ idx ∈ mg.active_move_indices_involving_1st 0,
    G idx (T.compute_cost_pair idx (T.prepare_cache12_backup s 0 (mg.get idx).2)
      (T.prepare_cache12 s (mg.get idx).2)).1 ∧
    G (MoveGenerators.get_twin_move_generator_index idx)
      (T.compute_cost_pair idx (T.prepare_cache12_backup s 0 (mg.get idx).2)
        (T.prepare_cache12 s (mg.get idx).2)).2)

/-- The deltas that `symmetric_init` computes from the caches of the operator `T` for the
base move of a move of an active list have the property `G`, for the customers and for the
depot. -/
def CommonOperator.BaseExact {K12 K1 K2 : Type} (T : AbstractOperator K12 K1 K2)
    (mg : MoveGenerators) (s : Solution) (G : Nat → Int → Prop) : Prop :=
  (∀ (i : Int) (idx : Nat), i ≠ 0 → idx ∈ mg.active_move_indices_involving_1st i →
    G (MoveGenerators.get_base_move_generator_index idx)
      (T.compute_cost_12_12 (MoveGenerators.get_base_move_generator_index idx)
        (T.prepare_cache12 s i)
        (if (mg.get idx).2 = 0 then T.prepare_cache12_backup s (mg.get idx).2 i
          else T.prepare_cache12 s (mg.get idx).2))) ∧
  (∀ idx ∈ mg.active_move_indices_involving_1st 0,
    G (MoveGenerators.get_base_move_generator_index idx)
      (T.compute_cost_12_12 (MoveGenerators.get_base_move_generator_index idx)
        (T.prepare_cache12_backup s 0 (mg.get idx).2) (T.prepare_cache12 s (mg.get idx).2)))

/-! ## OneOneExchange as an operator of the local search

The caches `Cache1` and `Cache2` of `src/localsearch/OneOneExchange.hpp`, the instances of
the template `compute_cost(move, i, j)`, the writes of `execute` to `storage` and to the
update bits, and the operator that `CommonOperator<OneOneExchange>` uses. -/

namespace OneOneExchange

/-- The struct `Cache1`. -/
structure Cache1 where
  v : Int
  prev : Int
  next : Int
  vrem : Int

/-- Method `prepare_cache1(solution, vertex)`, for a customer. -/
def prepare_cache1 (s : Solution) (vertex : Int) : Cache1 :=
  let route := s.get_route_index vertex
  let prev := s.get_prev_customer_vertex vertex
  let next := s.get_next_customer_vertex vertex
  { v := vertex
    prev := prev
    next := next
    vrem := -s.get_cost_prev_customer vertex - s.get_cost_prev_vertex route next }

/-- Method `prepare_cache1(solution, vertex, backup)`, for the depot. -/
def prepare_cache1_backup (s : Solution) (vertex backup : Int) : Cache1 :=
  let route := s.get_route_index backup
  let prev := s.get_last_customer route
  let next := s.get_first_customer route
  { v := vertex
    prev := prev
    next := next
    vrem := -s.get_cost_prev_depot route - s.get_cost_prev_customer next }

/-- The struct `Cache2`. -/
structure Cache2 where
  v : Int
  prev : Int
  prevprev : Int
  prevrem : Int

/-- Method `prepare_cache2(solution, vertex)`, for a customer. -/
def prepare_cache2 (s : Solution) (vertex : Int) : Cache2 :=
  let route := s.get_route_index vertex
  let prev := s.get_prev_customer_vertex vertex
  { v := vertex
    prev := prev
    prevprev := s.get_prev_vertex route prev
    prevrem := -s.get_cost_prev_vertex route prev - s.get_cost_prev_customer vertex }

/-- Method `prepare_cache2(solution, vertex, backup)`, for the depot. -/
def prepare_cache2_backup (s : Solution) (vertex backup : Int) : Cache2 :=
  let route := s.get_route_index backup
  let prev := s.get_last_customer route
  { v := vertex
    prev := prev
    prevprev := s.get_prev_customer_vertex prev
    prevrem := -s.get_cost_prev_customer prev - s.get_cost_prev_depot route }

/-- Method template `compute_cost(move, i, j)` for a `Cache12` and a `Cache2`. -/
def compute_cost_12_2 (I : Instance) (edge_cost : Int) (i : Cache12) (j : Cache2) : Int :=
  I.cost j.prevprev i.v + edge_cost + I.cost i.prev j.prev + I.cost j.prev i.next +
    i.vrem + j.prevrem

/-- Method template `compute_cost(move, i, j)` for a `Cache1` and a `Cache12`. -/
def compute_cost_1_12 (I : Instance) (edge_cost : Int) (i : Cache1) (j : Cache12) : Int :=
  I.cost j.prevprev i.v + edge_cost + I.cost i.prev j.prev + I.cost j.prev i.next +
    i.vrem + j.prevrem

/-- Method template `compute_cost(move, i, j)` for a `Cache1` and a `Cache2`. -/
def compute_cost_1_2 (I : Instance) (edge_cost : Int) (i : Cache1) (j : Cache2) : Int :=
  I.cost j.prevprev i.v + edge_cost + I.cost i.prev j.prev + I.cost j.prev i.next +
    i.vrem + j.prevrem

/-- The eight calls `storage.insert` of `execute`. -/
def affected (s : Solution) (i j : Int) (storage : SparseIntSet) : SparseIntSet :=
  let iRoute := s.get_route_index_fallback i j
  let jRoute := s.get_route_index_fallback j i
  let iPrev := s.get_prev_vertex iRoute i
  let iNext := s.get_next_vertex iRoute i
  let iNextNext := s.get_next_vertex iRoute iNext
  let jPrev := s.get_prev_vertex jRoute j
  let jPrevPrev := s.get_prev_vertex jRoute jPrev
  let jNext := s.get_next_vertex jRoute j
  (((((((storage.insert iPrev).insert i).insert iNext).insert iNextNext).insert
    jPrevPrev).insert jPrev).insert j).insert jNext

/-- The twelve writes of `execute` to the update bits. -/
def mark (s : Solution) (i j : Int) (bits : Int → Nat → Bool) : Int → Nat → Bool :=
  let iRoute := s.get_route_index_fallback i j
  let jRoute := s.get_route_index_fallback j i
  let iPrev := s.get_prev_vertex iRoute i
  let iNext := s.get_next_vertex iRoute i
  let iNextNext := s.get_next_vertex iRoute iNext
  let jPrev := s.get_prev_vertex jRoute j
  let jPrevPrev := s.get_prev_vertex jRoute jPrev
  let jNext := s.get_next_vertex jRoute j
  let b1 := set_update_bit bits iPrev UPDATE_BITS_FIRST true
  let b2 := set_update_bit b1 i UPDATE_BITS_FIRST true
  let b3 := set_update_bit b2 i UPDATE_BITS_SECOND true
  let b4 := set_update_bit b3 iNext UPDATE_BITS_FIRST true
  let b5 := set_update_bit b4 iNext UPDATE_BITS_SECOND true
  let b6 := set_update_bit b5 iNextNext UPDATE_BITS_SECOND true
  let b7 := set_update_bit b6 jPrevPrev UPDATE_BITS_FIRST true
  let b8 := set_update_bit b7 jPrev UPDATE_BITS_FIRST true
  let b9 := set_update_bit b8 jPrev UPDATE_BITS_SECOND true
  let b10 := set_update_bit b9 j UPDATE_BITS_FIRST true
  let b11 := set_update_bit b10 j UPDATE_BITS_SECOND true
  set_update_bit b11 jNext UPDATE_BITS_SECOND true

/-- The operator `OneOneExchange` as `CommonOperator` calls it, the move generator being
passed by its index in the registry `mg`. -/
def operator (I : Instance) (mg : MoveGenerators) : AbstractOperator Cache12 Cache1 Cache2 :=
  { is_symmetric := false
    pre_processing := fun s => s
    compute_cost := fun s move => compute_cost I s (mg.get move).1 (mg.get move).2
    is_feasible := fun s move => is_feasible I s (mg.get move).1 (mg.get move).2
    execute := fun s move storage bits =>
      (execute I s (mg.get move).1 (mg.get move).2,
        affected s (mg.get move).1 (mg.get move).2 storage,
        mark s (mg.get move).1 (mg.get move).2 bits)
    post_processing := fun s => s
    prepare_cache12 := prepare_cache12
    prepare_cache12_backup := prepare_cache12_backup
    prepare_cache1 := prepare_cache1
    prepare_cache1_backup := prepare_cache1_backup
    prepare_cache2 := prepare_cache2
    prepare_cache2_backup := prepare_cache2_backup
    compute_cost_pair := fun move i j => compute_cost_pair I (mg.get_edge_cost move) i j
    compute_cost_12_12 := fun move i j => compute_cost_cached I (mg.get_edge_cost move) i j
    compute_cost_12_2 := fun move i j => compute_cost_12_2 I (mg.get_edge_cost move) i j
    compute_cost_1_12 := fun move i j => compute_cost_1_12 I (mg.get_edge_cost move) i j
    compute_cost_1_2 := fun move i j => compute_cost_1_2 I (mg.get_edge_cost move) i j }

end OneOneExchange

/-- The registry `pairMG` with its two moves active: the active list of customer 1 holds
the move `(1, 2)`, that of customer 2 the move `(2, 1)`. -/
def pairActive : MoveGenerators :=
  { pairMG with
    active_move_indices_involving_1st :=
      fun v => if v = 1 then [0] else if v = 2 then [1] else [] }

/-! ## Solution::swap_tails -/

namespace Solution

/-- A loop `while (curr != depot)` of `swap_tails`: the customers of route `src` from `curr`
to the last one are moved, one after the other, in front of the vertex `wh` of route `dst`.
The first loop of the method is this loop for `jRoute`, `iRoute` and `iNext`, the second one
is this loop for `iRoute`, `jRoute` and the depot. -/
def swap_tails_loop (I : Instance) (src dst : Nat) (wh : Int) :
    Nat → Solution → Int → Option Solution
  | 0, _, _ => none
  | fuel + 1, s, curr =>
    if curr ≠ 0 then
      let next := (s.customers_list curr).next
      let s1 := (remove_vertex I s true src curr).1
      let s2 := insert_vertex_before I s1 true dst wh curr
      swap_tails_loop I src dst wh fuel s2 next
    else some s

/-- Method `swap_tails(i, iRoute, j, jRoute)`; each loop is given `fuel` passes. -/
def swap_tails (I : Instance) (s : Solution) (i : Int) (iRoute : Nat) (j : Int) (jRoute : Nat)
    (fuel : Nat) : Option Solution :=
  let iNext := (s.customers_list i).next
  match swap_tails_loop I jRoute iRoute iNext fuel s j with
  | none => none
  | some s1 =>
    match swap_tails_loop I iRoute jRoute 0 fuel s1 iNext with
    | none => none
    | some s2 =>
      some ((s2.set_route_needs_cumulative_load_update iRoute true
        ).set_route_needs_cumulative_load_update jRoute true)

end Solution
/-! ## The drivers of the local search

Shallow embedding of `RandomizedVariableNeighborhoodDescent::apply` and of
`VariableNeighborhoodDescentComposer::sequential_apply` of `src/localsearch/LocalSearch.hpp`.
The call `op->apply_rough_best_improvement(solution)` of an operator, and the call
`tiers[n]->apply(solution)` of a tier, is a function from solutions to solutions that returns
`none` when the call does not return. The permutation that `std::shuffle` draws is the
parameter `shuffle`. The tolerance is a rational number. -/

namespace RandomizedVariableNeighborhoodDescent

/-- Method `apply`, for the operators `run k` with `k` in `operators`; returns the solution,
the vector `operators` as the shuffle leaves it, and the log of the operators called, in the
order of the calls. -/
def apply (run : Nat → Solution → Option Solution) (shuffle : List Nat → List Nat)
    (operators : List Nat) (solution : Solution) : Option (Solution × List Nat × List Nat) :=
  let operators2 := shuffle operators
  (operators2.foldlM (fun (acc : Solution × List Nat) op =>
    (run op acc.1).map (fun s2 => (s2, acc.2 ++ [op]))) (solution, [])).map
    (fun r => (r.1, operators2, r.2))

end RandomizedVariableNeighborhoodDescent

namespace VariableNeighborhoodDescentComposer

/-- The `for` loop of `sequential_apply` from the tier of index `n` on, `tiers` being the
tiers that are left; the flag returned tells whether the loop was left by
`goto __again__`. -/
def tiers_loop (tolerance : ℚ) :
    Nat → List (Solution → Option Solution) → Solution → Option (Solution × Bool)
  | _, [], solution => some (solution, false)
  | n, tier :: rest, solution =>
    let curr_cost := solution.get_cost
    match tier solution with
    | none => none
    | some solution2 =>
      if n > 0 ∧ (solution2.get_cost : ℚ) + tolerance < (curr_cost : ℚ) then
        some (solution2, true)
      else tiers_loop tolerance (n + 1) rest solution2

/-- Method `sequential_apply`; one unit of fuel per pass through the `for` loop. Returns the
solution and the number of times that `goto __again__` was taken. -/
def sequential_apply (tolerance : ℚ) (tiers : List (Solution → Option Solution)) :
    Nat → Solution → Option (Solution × Nat)
  | 0, _ => none
  | fuel + 1, solution =>
    match tiers_loop tolerance 0 tiers solution with
    | none => none
    | some (solution2, true) =>
      (sequential_apply tolerance tiers fuel solution2).map (fun r => (r.1, r.2 + 1))
    | some (solution2, false) => some (solution2, 0)

end VariableNeighborhoodDescentComposer

/-- An operator given by its effect on the stored cost alone: a solution of cost `a` gets
the cost `b`, every other solution is left as it is. -/
def costOperator (a b : Int) (s : Solution) : Option Solution :=
  if s.get_cost = a then some (s.add_cost (b - a)) else some s

/-- A solution of cost 10. -/
def tenSolution : Solution := (Solution.fresh lineInstance 0).add_cost 10

/-- Two operators given by their effect on the cost: operator 0 lowers the cost 8 to 7,
every other operator lowers the cost 10 to 8. -/
def costOperators (op : Nat) : Solution → Option Solution :=
  if op = 0 then costOperator 8 7 else costOperator 10 8

/-- The tier that applies the operators 0 and 1 of `costOperators`, which the shuffle leaves
in this order. -/
def costTier (s : Solution) : Option Solution :=
  (RandomizedVariableNeighborhoodDescent.apply costOperators id [0, 1] s).map (fun r => r.1)

/-! ## The local search cycle

Shallow embedding of `CommonOperator::apply_rough_best_improvement` of
`src/localsearch/AbstractOperator.hpp`: the scan of the heap for the next move, the
statements that execute it and update the deltas, the loop, and the check
`__check_deltas`. The assertions of the method are not part of the model; they are stated
as theorems. -/

namespace CommonOperator

section Cycle

variable {K12 K1 K2 : Type} (T : AbstractOperator K12 K1 K2) (mg : MoveGenerators)
  (tolerance : Int) (handle_partial_solutions : Bool)

/-- Method `__check_deltas`. The deltas being exact numbers, the test
`fabs(delta - compute_cost) > 0.01` is the test that the two differ. -/
def check_deltas (s : Solution) (st : CommonOperator) : Bool :=
  (List.range st.heap.size).all (fun i =>
    let move := st.heap.heap i
    if !T.is_feasible s move then true
    else decide (st.heap.delta move = T.compute_cost s move))

/-- The scan `while (index < heap.size())` of `apply_rough_best_improvement` from
`index = 0` up to the first move that passes the tests: the position of this move in the
heap, if there is one. -/
def next_move (s : Solution) (st : CommonOperator) : Option Nat :=
  (List.range st.heap.size).find? (fun index =>
    let move := st.heap.heap index
    !(handle_partial_solutions &&
        (!s.is_vertex_in_solution (mg.get move).1 ||
          !s.is_vertex_in_solution (mg.get move).2)) &&
      T.is_feasible s move)

/-- The statements of the loop of `apply_rough_best_improvement` for a move that passes
the tests: `execute`, `descriptors_update` and `affected_vertices.clear()`. -/
def apply_move (s : Solution) (st : CommonOperator) (move : Nat) :
    Option (Solution × CommonOperator) :=
  let r := T.execute s move st.affected_vertices st.update_bits
  let st1 := { st with affected_vertices := r.2.1, update_bits := r.2.2 }
  (descriptors_update T mg tolerance handle_partial_solutions r.1 st1).map (fun st2 =>
    (r.1, { st2 with affected_vertices := st2.affected_vertices.clear }))

/-- The loop of `apply_rough_best_improvement`; the third component is `improved`. -/
def search_loop : Nat → Solution → CommonOperator → Bool →
    Option (Solution × CommonOperator × Bool)
  | 0, _, _, _ => none
  | fuel + 1, s, st, improved =>
    match next_move T mg handle_partial_solutions s st with
    | none => some (s, st, improved)
    | some index =>
      match apply_move T mg tolerance handle_partial_solutions s st (st.heap.heap index) with
      | none => none
      | some r => search_loop fuel r.1 r.2 true

/-- The state in which `apply_rough_best_improvement` calls `initialize_descriptors`: the
heap has been reset; the two logs start empty. -/
def start (st : CommonOperator) : CommonOperator :=
  { st with heap := st.heap.reset, evaluated := [], inserted := [] }

/-- Method `apply_rough_best_improvement`. -/
def apply_rough_best_improvement (fuel svc_fuel : Nat) (s : Solution) (st : CommonOperator) :
    Option (Solution × CommonOperator × Bool) :=
  let s1 := T.pre_processing s
  match initialize_descriptors T mg tolerance handle_partial_solutions s1 svc_fuel
      st.start with
  | none => none
  | some st1 =>
    (search_loop T mg tolerance handle_partial_solutions fuel s1 st1 false).map
      (fun r => (T.post_processing r.1, r.2.1, r.2.2))

/-- The states of a cycle started on `s0` and `st0` in which the method asserts
`__check_deltas`: the state after `initialize_descriptors`, and the state after each
executed move and the `descriptors_update` that follows it. -/
inductive Checked (svc_fuel : Nat) (s0 : Solution) (st0 : CommonOperator) :
    Solution → CommonOperator → Prop
  | init (st1 : CommonOperator) :
    initialize_descriptors T mg tolerance handle_partial_solutions (T.pre_processing s0)
      svc_fuel st0.start = some st1 → Checked svc_fuel s0 st0 (T.pre_processing s0) st1
  | step (s : Solution) (st : CommonOperator) (index : Nat)
    (r : Solution × CommonOperator) : Checked svc_fuel s0 st0 s st →
    next_move T mg handle_partial_solutions s st = some index →
    apply_move T mg tolerance handle_partial_solutions s st (st.heap.heap index) = some r →
    Checked svc_fuel s0 st0 r.1 r.2

end Cycle

end CommonOperator

/-- The instance with the depot and four customers at the positions 0 to 4 of a line,
unit demands and capacity 10. -/
def pathInstance : Instance :=
  { vertices_num := 5
    cost := fun i j => |i - j|
    demand := fun v => if v = 0 then 0 else 1
    vehicle_capacity := 10 }

/-- The solution of `pathInstance` with the route `1: depot, 1, depot`, with a cache of five
entries. -/
def pathOne : Solution :=
  (Solution.build_one_customer_route pathInstance (Solution.fresh pathInstance 5) true 1).2

/-- The solution with the route `1: depot, 1, 2, depot`. -/
def pathTwo : Solution := Solution.insert_vertex_before pathInstance pathOne true 1 0 2

/-- The solution with the routes `1: depot, 1, 2, depot` and `2: depot, 3, depot`. -/
def pathThree : Solution := (Solution.build_one_customer_route pathInstance pathTwo true 3).2

/-- The solution of `pathInstance` with the routes `1: depot, 1, 2, depot`,
`2: depot, 3, depot` and `3: depot, 4, depot`. -/
def pathSol : Solution := (Solution.build_one_customer_route pathInstance pathThree true 4).2

/-- The cyclic lists describing the routes of `pathOne`. -/
def pathOneA : Nat → List Int := upd (fun _ => []) 1 [0, 1]

/-- The cyclic lists describing the routes of `pathTwo`. -/
def pathTwoA : Nat → List Int := upd pathOneA 1 [2, 0, 1]

/-- The cyclic lists describing the routes of `pathThree`. -/
def pathThreeA : Nat → List Int := upd pathTwoA 2 [0, 3]

/-- The cyclic lists describing the routes of `pathSol`. -/
def pathSolA : Nat → List Int := upd pathThreeA 3 [0, 4]

/-- The registry of `pathInstance` with the moves `(2, 3)`, `(3, 2)`, `(2, 4)` and `(4, 2)`,
all active. -/
def pathMG : MoveGenerators :=
  { MoveGenerators.init pathInstance 1 with
    moves := [(2, 3), (3, 2), (2, 4), (4, 2)]
    edge_costs := [1, 2]
    active_move_indices_involving_1st :=
      fun v => if v = 2 then [0, 2] else if v = 3 then [1] else if v = 4 then [3] else [] }

/-- In the cyclic list `l` the vertex `x` is followed by the vertex `y`. -/
def CycNext (l : List Int) (x y : Int) : Prop := ∃ t, l ~r (x :: y :: t)

namespace OneOneExchange

/-- The vertices whose update bit `UPDATE_BITS_FIRST` the method `execute` sets. -/
def marked_first (s : Solution) (i j : Int) : List Int :=
  let iRoute := s.get_route_index_fallback i j
  let jRoute := s.get_route_index_fallback j i
  let iPrev := s.get_prev_vertex iRoute i
  let iNext := s.get_next_vertex iRoute i
  let jPrev := s.get_prev_vertex jRoute j
  let jPrevPrev := s.get_prev_vertex jRoute jPrev
  [iPrev, i, iNext, jPrevPrev, jPrev, j]

/-- The vertices whose update bit `UPDATE_BITS_SECOND` the method `execute` sets. -/
def marked_second (s : Solution) (i j : Int) : List Int :=
  let iRoute := s.get_route_index_fallback i j
  let jRoute := s.get_route_index_fallback j i
  let iNext := s.get_next_vertex iRoute i
  let iNextNext := s.get_next_vertex iRoute iNext
  let jPrev := s.get_prev_vertex jRoute j
  let jNext := s.get_next_vertex jRoute j
  [i, iNext, iNextNext, jPrev, j, jNext]

end OneOneExchange

namespace CommonOperator

/-- The move `m`, if it is in the heap, has the delta `V m`. -/
def Correct (V : Nat → Int) (st : CommonOperator) (m : Nat) : Prop :=
  st.heap.heap_index m ≠ -1 → st.heap.delta m = V m

/-- Invariant of `asymmetric_update` with the timestamp `ct`, for the deltas `V` of the
current solution: the heap is consistent; a move in the heap is a move of the active list
of its first endpoint and its delta is not above `-tolerance`; its delta is `V` when neither
its first endpoint carries the first update bit nor its second endpoint the second one, or
when one of them carries this bit and the timestamp; a vertex with the timestamp carries an
update bit. -/
structure UpdInv (mg : MoveGenerators) (tolerance : Int) (V : Nat → Int) (ct : Nat)
    (st : CommonOperator) : Prop where
  heap_ok : st.heap.OK
  act : ∀ m, st.heap.heap_index m ≠ -1 →
    m < mg.size ∧ m ∈ mg.active_move_indices_involving_1st (mg.get m).1
  low : ∀ m, st.heap.heap_index m ≠ -1 → st.heap.delta m ≤ -tolerance
  val : ∀ m, st.heap.heap_index m ≠ -1 →
    ((st.update_bits (mg.get m).1 UPDATE_BITS_FIRST = false ∧
        st.update_bits (mg.get m).2 UPDATE_BITS_SECOND = false) ∨
      (st.update_bits (mg.get m).1 UPDATE_BITS_FIRST = true ∧
        st.vertex_timestamp (mg.get m).1 = ct) ∨
      (st.update_bits (mg.get m).2 UPDATE_BITS_SECOND = true ∧
        st.vertex_timestamp (mg.get m).2 = ct)) →
    st.heap.delta m = V m
  marked : ∀ v, st.vertex_timestamp v = ct →
    st.update_bits v UPDATE_BITS_FIRST = true ∨ st.update_bits v UPDATE_BITS_SECOND = true

/-- The deltas that `asymmetric_update` computes from the caches of the operator `T` on the
solution `s` are the deltas `V`: for a move `idx` of the active list of a customer `i` and
for its twin, in each of the branches of the three loops, and likewise for the depot. -/
structure UpdExact {K12 K1 K2 : Type} (T : AbstractOperator K12 K1 K2) (mg : MoveGenerators)
    (s : Solution) (V : Nat → Int) : Prop where
  both_first : ∀ (i : Int) (idx : Nat), i ≠ 0 →
    idx ∈ mg.active_move_indices_involving_1st i →
    T.compute_cost_12_2 idx (T.prepare_cache12 s i)
      (if (mg.get idx).2 = 0 then T.prepare_cache2_backup s (mg.get idx).2 i
        else T.prepare_cache2 s (mg.get idx).2) = V idx
  both_second : ∀ (i : Int) (idx : Nat), i ≠ 0 →
    idx ∈ mg.active_move_indices_involving_1st i →
    T.compute_cost_1_12 (MoveGenerators.get_twin_move_generator_index idx)
      (if (mg.get idx).2 = 0 then T.prepare_cache1_backup s (mg.get idx).2 i
        else T.prepare_cache1 s (mg.get idx).2) (T.prepare_cache12 s i) =
      V (MoveGenerators.get_twin_move_generator_index idx)
  both_pair : ∀ (i : Int) (idx : Nat), i ≠ 0 →
    idx ∈ mg.active_move_indices_involving_1st i →
    T.compute_cost_pair (MoveGenerators.get_twin_move_generator_index idx)
      (T.prepare_cache12 s i)
      (if (mg.get idx).2 = 0 then T.prepare_cache12_backup s (mg.get idx).2 i
        else T.prepare_cache12 s (mg.get idx).2) =
      (V idx, V (MoveGenerators.get_twin_move_generator_index idx))
  first : ∀ (i : Int) (idx : Nat), i ≠ 0 →
    idx ∈ mg.active_move_indices_involving_1st i →
    T.compute_cost_1_2 idx (T.prepare_cache1 s i)
      (if (mg.get idx).2 = 0 then T.prepare_cache2_backup s (mg.get idx).2 i
        else T.prepare_cache2 s (mg.get idx).2) = V idx
  second : ∀ (i : Int) (m : Nat), i ≠ 0 →
    m ∈ mg.get_move_generator_indices_involving_2nd i →
    T.compute_cost_1_2 m
      (if (mg.get m).1 = 0 then T.prepare_cache1_backup s (mg.get m).1 i
        else T.prepare_cache1 s (mg.get m).1) (T.prepare_cache2 s i) = V m
  depot_first : ∀ idx ∈ mg.active_move_indices_involving_1st 0,
    T.compute_cost_1_2 idx (T.prepare_cache1_backup s 0 (mg.get idx).2)
      (T.prepare_cache2 s (mg.get idx).2) = V idx
  depot_second : ∀ m ∈ mg.get_move_generator_indices_involving_2nd 0,
    T.compute_cost_1_2 m (T.prepare_cache1 s (mg.get m).1)
      (T.prepare_cache2_backup s 0 (mg.get m).1) = V m
  depot_pair : ∀ idx ∈ mg.active_move_indices_involving_1st 0,
    T.compute_cost_pair idx (T.prepare_cache12_backup s 0 (mg.get idx).2)
      (T.prepare_cache12 s (mg.get idx).2) =
      (V idx, V (MoveGenerators.get_twin_move_generator_index idx))

end CommonOperator

namespace OneOneExchange

/-- The `Cache1` that the local search prepares for the endpoint `vertex` of a move whose
other endpoint is `other`. -/
def cache1_of (s : Solution) (vertex other : Int) : Cache1 :=
  if vertex = 0 then prepare_cache1_backup s vertex other else prepare_cache1 s vertex

/-- The `Cache2` that the local search prepares for the endpoint `vertex` of a move whose
other endpoint is `other`. -/
def cache2_of (s : Solution) (vertex other : Int) : Cache2 :=
  if vertex = 0 then prepare_cache2_backup s vertex other else prepare_cache2 s vertex

/-- The state of a local search cycle of OneOneExchange between two moves: the solution is
consistent, each of its routes serves a customer, the customers of the moves of the
registry are served; the heap is consistent, a move in the heap is a move of
the active list of its first endpoint, its delta is `compute_cost` on the solution and is
not above `-tolerance`; no vertex timestamp exceeds the value of the timestamp generator,
no update bit is set and the set of the affected vertices is empty. -/
structure CycleInv (I : Instance) (mg : MoveGenerators) (tolerance : Int) (s : Solution)
    (st : CommonOperator) : Prop where
  rep : ∃ A, Rep I s A ∧ CostOK I s A ∧ (∀ r, A r ≠ [] → (0 : Int) ∈ A r) ∧
    (∀ r, A r ≠ [] → ∃ c ∈ A r, c ≠ 0)
  served : ∀ idx, idx < mg.size →
    ((mg.get idx).1 ≠ 0 → (s.customers_list (mg.get idx).1).route_ptr ≠ 0) ∧
    ((mg.get idx).2 ≠ 0 → (s.customers_list (mg.get idx).2).route_ptr ≠ 0)
  heap_ok : st.heap.OK
  act : ∀ m, st.heap.heap_index m ≠ -1 →
    m < mg.size ∧ m ∈ mg.active_move_indices_involving_1st (mg.get m).1
  low : ∀ m, st.heap.heap_index m ≠ -1 → st.heap.delta m ≤ -tolerance
  val : ∀ m, st.heap.heap_index m ≠ -1 →
    st.heap.delta m = compute_cost I s (mg.get m).1 (mg.get m).2
  stamps : ∀ v, st.vertex_timestamp v ≤ st.timegen
  bits : ∀ v k, st.update_bits v k = false
  no_affected : st.affected_vertices.elements = [] ∧ ∀ v, st.affected_vertices.flags v = false

end OneOneExchange

/-- The state of the local search on `pathSol` with the registry `pathMG` after the
initialization with the given tolerance. -/
def pathInit (tolerance : Int) : CommonOperator :=
  (CommonOperator.initialize_descriptors (OneOneExchange.operator pathInstance pathMG) pathMG
    tolerance false pathSol 5 idleOperator.start).getD idleOperator

/-- The solution and the state of the local search after the move `(3, 2)`, the move
generator 1 of `pathMG`, has been executed on `pathSol` and the deltas have been
updated. -/
def pathNext (tolerance : Int) : Solution × CommonOperator :=
  (CommonOperator.apply_move (OneOneExchange.operator pathInstance pathMG) pathMG tolerance
    false pathSol (pathInit tolerance) 1).getD (pathSol, idleOperator)
/-! ## Values of type double

A finite value of type `double` is the rational number it holds. The arithmetic of the
source on `double`s is the exact operation followed by the rounding `binary64` to the
nearest value of the format (IEEE 754 binary64: 53 binary digits, the least exponent
`-1022`, denormalised numbers below it; a tie goes to the even neighbour). The rounding is
computed for every rational number; results of magnitude `2 ^ 1024` or more, which the
format replaces by an infinity, are marked by the type `Dbl` below where the source can
reach them. -/

/-- The power `2 ^ e` as a rational number. -/
def pow2 (e : Int) : ℚ :=
  if 0 ≤ e then ((2 ^ e.toNat : Nat) : ℚ) else 1 / ((2 ^ (-e).toNat : Nat) : ℚ)

/-- The number of binary digits of `n` less one, computed with fuel `f`. -/
def log2_fuel : Nat → Nat → Nat
  | 0, _ => 0
  | f + 1, n => if n < 2 then 0 else log2_fuel f (n / 2) + 1

/-- The number of binary digits of `n` less one: `2 ^ log2 n ≤ n < 2 ^ (log2 n + 1)` for
`n > 0`. -/
def log2 (n : Nat) : Nat := log2_fuel n n

/-- The exponent of a positive rational number `a`: the integer `e` with
`2 ^ e ≤ a < 2 ^ (e + 1)`. -/
def exponent (a : ℚ) : Int :=
  if pow2 ((log2 a.num.natAbs : Int) - (log2 a.den : Int)) ≤ a then
    (log2 a.num.natAbs : Int) - (log2 a.den : Int)
  else (log2 a.num.natAbs : Int) - (log2 a.den : Int) - 1

/-- Rounding to the nearest integer, a tie to the even one. -/
def round_even (y : ℚ) : Int :=
  if y - ⌊y⌋ < 1 / 2 then ⌊y⌋
  else if 1 / 2 < y - ⌊y⌋ then ⌊y⌋ + 1
  else if ⌊y⌋ % 2 = 0 then ⌊y⌋ else ⌊y⌋ + 1

/-- The distance `2 ^ (max(e, -1022) - 52)` of the values of type `double` around the
number `x` of exponent `e`. -/
def quantum (x : ℚ) : ℚ := pow2 (max (exponent |x|) (-1022) - 52)

/-- The value of type `double` nearest to the rational number `x`, a tie going to the value
with the even last digit; the exponent is not bounded from above. -/
def binary64 (x : ℚ) : ℚ :=
  if x = 0 then 0 else (round_even (x / quantum x) : ℚ) * quantum x

/-- A value of type `double`: a finite number, an infinity or NaN. The two zeros of the
format are the one number 0, which stands for the positive zero. -/
inductive Dbl
  | fin (q : ℚ)
  | pinf
  | ninf
  | nan
  deriving DecidableEq

namespace Dbl

/-- The value that the format gives to the exact result `x` of an operation: the nearest
value, or an infinity when this lies beyond the largest finite value. -/
def round (x : ℚ) : Dbl :=
  if pow2 1024 ≤ binary64 x then pinf
  else if binary64 x ≤ - pow2 1024 then ninf
  else fin (binary64 x)

/-- The addition of two values of type `double`. -/
def add : Dbl → Dbl → Dbl
  | fin a, fin b => round (a + b)
  | fin _, pinf => pinf
  | fin _, ninf => ninf
  | pinf, fin _ => pinf
  | pinf, pinf => pinf
  | ninf, fin _ => ninf
  | ninf, ninf => ninf
  | _, _ => nan

/-- The multiplication of two values of type `double`. -/
def mul : Dbl → Dbl → Dbl
  | fin a, fin b => round (a * b)
  | fin a, pinf => if 0 < a then pinf else if a < 0 then ninf else nan
  | fin a, ninf => if 0 < a then ninf else if a < 0 then pinf else nan
  | pinf, fin b => if 0 < b then pinf else if b < 0 then ninf else nan
  | ninf, fin b => if 0 < b then ninf else if b < 0 then pinf else nan
  | pinf, pinf => pinf
  | ninf, ninf => pinf
  | pinf, ninf => ninf
  | ninf, pinf => ninf
  | _, _ => nan

/-- The division of two values of type `double`; a divisor 0 is the positive zero. -/
def div : Dbl → Dbl → Dbl
  | fin a, fin b =>
    if b = 0 then (if 0 < a then pinf else if a < 0 then ninf else nan) else round (a / b)
  | fin _, pinf => fin 0
  | fin _, ninf => fin 0
  | pinf, fin b => if 0 ≤ b then pinf else ninf
  | ninf, fin b => if 0 ≤ b then ninf else pinf
  | _, _ => nan

/-- The function `std::ceil`. -/
def ceil : Dbl → Dbl
  | fin a => fin (⌈a⌉ : Int)
  | x => x

/-- The comparison `<` of two values of type `double`; it is false when one is NaN. -/
def lt : Dbl → Dbl → Bool
  | fin a, fin b => decide (a < b)
  | fin _, pinf => true
  | ninf, fin _ => true
  | ninf, pinf => true
  | _, _ => false

/-- The conversion `(int)` of a value of type `double`: the fraction is dropped; the
conversion is undefined (`none`) for NaN, the infinities and the numbers whose whole part
is not a value of type `int`. -/
def toInt : Dbl → Option Int
  | fin a =>
    if -2147483648 ≤ (if 0 ≤ a then ⌊a⌋ else ⌈a⌉) ∧ (if 0 ≤ a then ⌊a⌋ else ⌈a⌉) ≤ 2147483647
    then some (if 0 ≤ a then ⌊a⌋ else ⌈a⌉) else none
  | _ => none

end Dbl

/-- The sum of two finite values of type `double`. -/
def fadd (a b : ℚ) : ℚ := binary64 (a + b)

/-- The difference of two finite values of type `double`. -/
def fsub (a b : ℚ) : ℚ := binary64 (a - b)

/-- The product of two finite values of type `double`. -/
def fmul (a b : ℚ) : ℚ := binary64 (a * b)
/-! ## The checks of the constructor of Params

Shallow embedding of the part of `Params::Params` (`src/Program/Params.cpp`) that decides
whether the constructor throws. The data of the instance are finite values of type
`double`, given as rational numbers; the computed `totalDemand` and the quotients are
values of the type `Dbl`, with the rounding, the infinities and NaN of the format. The
literals `0.1` and `1.3` are the values of type `double` nearest to `1/10` and `13/10`;
`INT_MAX` is `2147483647`. The vector `demands` is a list, the matrix `dist_mtx` a function
of two indices. The coordinates, the service times and the correlated vertices do not enter
the checks and are left out. The result `none` stands for undefined behaviour: the
conversion `(int)` of a value that is not in the range of `int`, or the overflow of the
addition `+ 3`. -/

namespace Params

/-- The members that the constructor has computed when it reaches its checks. -/
structure Scales where
  nbClients : Int
  totalDemand : Dbl
  maxDemand : ℚ
  nbVehicles : Int
  maxDist : ℚ

/-- One pass through the loop over the clients: `maxDemand` and `totalDemand`. -/
def demand_step (demands : List ℚ) (acc : ℚ × Dbl) (i : Nat) : ℚ × Dbl :=
  (if demands.getD i 0 > acc.1 then demands.getD i 0 else acc.1,
    Dbl.add acc.2 (Dbl.fin (demands.getD i 0)))

/-- The loop over the clients `0 .. nbClients`: `maxDemand` and `totalDemand`. -/
def demand_loop (demands : List ℚ) : ℚ × Dbl :=
  (List.range ((demands.length : Int) - 1 + 1).toNat).foldl (demand_step demands) (0, Dbl.fin 0)

/-- One pass through the inner loop of the calculation of the maximum distance. -/
def dist_step (dist_mtx : Nat → Nat → ℚ) (i : Nat) (maxDist : ℚ) (j : Nat) : ℚ :=
  if dist_mtx i j > maxDist then dist_mtx i j else maxDist

/-- The calculation of the maximum distance. -/
def max_dist (dist_mtx : Nat → Nat → ℚ) (nbClients : Int) : ℚ :=
  (List.range (nbClients + 1).toNat).foldl
    (fun m i => (List.range (nbClients + 1).toNat).foldl (dist_step dist_mtx i) m) 0

/-- The default fleet size `(int)std::ceil(1.3*totalDemand/vehicleCapacity) + 3`. -/
def default_fleet (totalDemand : Dbl) (vehicleCapacity : ℚ) : Option Int :=
  match Dbl.toInt (Dbl.ceil (Dbl.div (Dbl.mul (Dbl.fin (binary64 (13 / 10))) totalDemand)
      (Dbl.fin vehicleCapacity))) with
  | some n => if n + 3 ≤ 2147483647 then some (n + 3) else none
  | none => none

/-- The fleet size in force: the given one, or the default when none is given
(`INT_MAX`). -/
def fleet (demands : List ℚ) (vehicleCapacity : ℚ) (nbVeh : Int) : Option Int :=
  if nbVeh = 2147483647 then default_fleet (demand_loop demands).2 vehicleCapacity
  else some nbVeh

/-- The value `std::ceil(totalDemand / vehicleCapacity)` of the last check. -/
def needed (demands : List ℚ) (vehicleCapacity : ℚ) : Dbl :=
  Dbl.ceil (Dbl.div (demand_loop demands).2 (Dbl.fin vehicleCapacity))

/-- The constructor `Params::Params`, up to its checks: the members computed, or the message
thrown. -/
def construct (dist_mtx : Nat → Nat → ℚ) (demands : List ℚ) (vehicleCapacity : ℚ)
    (nbVeh : Int) : Option (Except String Scales) :=
  let nbClients : Int := (demands.length : Int) - 1
  let maxDemand := (demand_loop demands).1
  let totalDemand := (demand_loop demands).2
  match (if nbVeh = 2147483647 then default_fleet totalDemand vehicleCapacity
      else some nbVeh) with
  | none => none
  | some nbVehicles =>
    let maxDist := max_dist dist_mtx nbClients
    if maxDist < binary64 (1 / 10) ∨ maxDist > 100000 then
      some (Except.error "The distances are of very small or large scale. This could impact numerical stability. Please rescale the dataset and run again.")
    else if maxDemand < binary64 (1 / 10) ∨ maxDemand > 100000 then
      some (Except.error "The demand quantities are of very small or large scale. This could impact numerical stability. Please rescale the dataset and run again.")
    else if Dbl.lt (Dbl.fin (nbVehicles : ℚ))
        (Dbl.ceil (Dbl.div totalDemand (Dbl.fin vehicleCapacity))) = true then
      some (Except.error "Fleet size is insufficient to service the considered clients.")
    else
      some (Except.ok { nbClients := nbClients, totalDemand := totalDemand,
                        maxDemand := maxDemand, nbVehicles := nbVehicles, maxDist := maxDist })

/-- The constructor throws; `none` when its behaviour is undefined. -/
def throws (dist_mtx : Nat → Nat → ℚ) (demands : List ℚ) (vehicleCapacity : ℚ)
    (nbVeh : Int) : Option Bool :=
  match construct dist_mtx demands vehicleCapacity nbVeh with
  | some (Except.error _) => some true
  | some (Except.ok _) => some false
  | none => none

end Params
/-! ## Split

Shallow embedding of `src/Program/Split.cpp` and `src/Program/Split.h`. The values of type
`double` of the source (demands, distances, penalties, potentials) are finite values, held
as rational numbers, and every operation of the source on them is the operation of the
format: `fadd`, `fsub` and `fmul` round the exact result to the nearest value of type
`double`, each operation on its own (no fused multiplication and addition), in the order
in which C++ evaluates the expression (from left to right). The
literals `1.e30` and `1.e29` are the constants `INF` and `LIM`, the values of type `double`
nearest to `10 ^ 30` and `10 ^ 29`; the literal `1.5` is the number `3/2`. The constant
`MY_EPSILON` is defined in `Params.h`, which is not among the sources: it is the field
`EPS` of the parameters. `std::max<double>(x, 0.)` is the larger of `x` and 0. The `throw`
of `splitSimple` and `splitLF` is the result `none`, as is the undefined conversion to
`int` of a quotient that is not in the range of `int`. The vectors are total functions from
the index; `chromT` is a list. The sums and products of `Split` are modelled for finite
results: a result of magnitude `2 ^ 1024` or more, which the format replaces by an
infinity, does not occur on the instances that `Params` accepts (distances and demands at
most `100000`) with penalties, capacity and durations of ordinary size. Only the quotient
`totalDemand / vehicleCapacity`, whose divisor may be 0, is computed in the type `Dbl`. -/

/-- Writing one cell of a matrix, `m[k][j] = v`. -/
def upd2 {α : Type} (m : Nat → Nat → α) (k j : Nat) (v : α) : Nat → Nat → α :=
  upd m k (upd (m k) j v)

/-- The fields of `Params` that `Split` reads, and the constant `MY_EPSILON`. -/
structure Params where
  nbClients : Nat
  nbVehicles : Nat
  demand : Int → ℚ
  serviceDuration : Int → ℚ
  timeCost : Int → Int → ℚ
  vehicleCapacity : ℚ
  durationLimit : ℚ
  penaltyCapacity : ℚ
  penaltyDuration : ℚ
  isDurationConstraint : Bool
  totalDemand : ℚ
  EPS : ℚ

/-- The struct `ClientSplit`. -/
structure ClientSplit where
  demand : ℚ
  serviceTime : ℚ
  d0_x : ℚ
  dx_0 : ℚ
  dnext : ℚ

/-- The struct `Trivial_Deque`. -/
structure Trivial_Deque where
  myDeque : Int → Nat
  indexFront : Int
  indexBack : Int

namespace Trivial_Deque

/-- Constructor `Trivial_Deque(nbElements, firstNode)`. -/
def create (firstNode : Nat) : Trivial_Deque :=
  { myDeque := upd (fun _ => 0) 0 firstNode, indexFront := 0, indexBack := 0 }

/-- Method `pop_front`. -/
def pop_front (q : Trivial_Deque) : Trivial_Deque := { q with indexFront := q.indexFront + 1 }

/-- Method `pop_back`. -/
def pop_back (q : Trivial_Deque) : Trivial_Deque := { q with indexBack := q.indexBack - 1 }

/-- Method `push_back`. -/
def push_back (q : Trivial_Deque) (i : Nat) : Trivial_Deque :=
  { q with indexBack := q.indexBack + 1, myDeque := upd q.myDeque (q.indexBack + 1) i }

/-- Method `get_front`. -/
def get_front (q : Trivial_Deque) : Nat := q.myDeque q.indexFront

/-- Method `get_next_front`. -/
def get_next_front (q : Trivial_Deque) : Nat := q.myDeque (q.indexFront + 1)

/-- Method `get_back`. -/
def get_back (q : Trivial_Deque) : Nat := q.myDeque q.indexBack

/-- Method `reset`. -/
def reset (q : Trivial_Deque) (firstNode : Nat) : Trivial_Deque :=
  { q with myDeque := upd q.myDeque 0 firstNode, indexBack := 0, indexFront := 0 }

/-- Method `size`. -/
def size (q : Trivial_Deque) : Int := q.indexBack - q.indexFront + 1

end Trivial_Deque

/-- The parts of `Individual` that `Split` reads and writes: the giant tour `chromT` and
the routes `chromR`. -/
structure Individual where
  chromT : List Int
  chromR : Nat → List Int

/-- The data members of the class `Split`. -/
structure Split where
  maxVehicles : Int
  cliSplit : Nat → ClientSplit
  potential : Nat → Nat → ℚ
  pred : Nat → Nat → Nat
  sumDistance : Nat → ℚ
  sumLoad : Nat → ℚ
  sumService : Nat → ℚ

namespace Split

/-- The literal `1.e30`: the value of type `double` nearest to `10 ^ 30`. -/
def INF : ℚ := 1000000000000000019884624838656

/-- The literal `1.e29`: the value of type `double` nearest to `10 ^ 29`. -/
def LIM : ℚ := 99999999999999991433150857216

/-- Constructor `Split(params)`. -/
def create (_p : Params) : Split :=
  { maxVehicles := 0
    cliSplit := fun _ => ⟨0, 0, 0, 0, 0⟩
    potential := fun _ _ => INF
    pred := fun _ _ => 0
    sumDistance := fun _ => 0
    sumLoad := fun _ => 0
    sumService := fun _ => 0 }

/-- Method `propagate(i, j, k)`. -/
def propagate (sp : Split) (p : Params) (i j k : Nat) : ℚ :=
  fadd (fadd (fadd (fsub (fadd (sp.potential k i) (sp.sumDistance j)) (sp.sumDistance (i + 1)))
    (sp.cliSplit (i + 1)).d0_x) (sp.cliSplit j).dx_0)
    (fmul p.penaltyCapacity (max (fsub (fsub (sp.sumLoad j) (sp.sumLoad i)) p.vehicleCapacity) 0))

/-- Method `dominates(i, j, k)`. -/
def dominates (sp : Split) (p : Params) (i j k : Nat) : Bool :=
  decide (fadd (sp.potential k j) (sp.cliSplit (j + 1)).d0_x >
    fadd (fsub (fadd (fadd (sp.potential k i) (sp.cliSplit (i + 1)).d0_x)
      (sp.sumDistance (j + 1))) (sp.sumDistance (i + 1)))
      (fmul p.penaltyCapacity (fsub (sp.sumLoad j) (sp.sumLoad i))))

/-- Method `dominatesRight(i, j, k)`. -/
def dominatesRight (sp : Split) (p : Params) (i j k : Nat) : Bool :=
  decide (fadd (sp.potential k j) (sp.cliSplit (j + 1)).d0_x <
    fadd (fsub (fadd (fadd (sp.potential k i) (sp.cliSplit (i + 1)).d0_x)
      (sp.sumDistance (j + 1))) (sp.sumDistance (i + 1))) p.EPS)

/-- The body of the first loop of `generalSplit`, for position `i` of the tour. -/
def prepare_step (p : Params) (T : List Int) (sp : Split) (i : Nat) : Split :=
  let c := T.getD (i - 1) 0
  let cs : ClientSplit :=
    { demand := p.demand c, serviceTime := p.serviceDuration c, d0_x := p.timeCost 0 c,
      dx_0 := p.timeCost c 0,
      dnext := if i < p.nbClients then p.timeCost c (T.getD i 0) else - INF }
  let sp1 : Split := { sp with cliSplit := upd sp.cliSplit i cs }
  let sp2 : Split :=
    { sp1 with sumLoad := upd sp1.sumLoad i (fadd (sp1.sumLoad (i - 1)) (sp1.cliSplit i).demand) }
  let sp3 : Split :=
    { sp2 with
      sumService :=
        upd sp2.sumService i (fadd (sp2.sumService (i - 1)) (sp2.cliSplit i).serviceTime) }
  { sp3 with
    sumDistance :=
      upd sp3.sumDistance i (fadd (sp3.sumDistance (i - 1)) (sp3.cliSplit (i - 1)).dnext) }

/-- The first loop of `generalSplit`, `for i in 1 .. nbClients`. -/
def prepare (p : Params) (T : List Int) (sp : Split) : Split :=
  (List.range p.nbClients).foldl (fun (s : Split) (m : Nat) => prepare_step p T s (m + 1)) sp

/-- The value of `cost` in the inner loop of the Bellman algorithm:
`distance + dx_0 + penaltyCapacity * max(load - vehicleCapacity, 0) +
penaltyDuration * max(distance + dx_0 + serviceDuration - durationLimit, 0)`. -/
def route_cost (p : Params) (distance dx_0 load serviceDuration : ℚ) : ℚ :=
  fadd (fadd (fadd distance dx_0)
      (fmul p.penaltyCapacity (max (fsub load p.vehicleCapacity) 0)))
    (fmul p.penaltyDuration
      (max (fsub (fadd (fadd distance dx_0) serviceDuration) p.durationLimit) 0))

/-- The inner loop `for j = i + 1; j <= nbClients && load <= 1.5 * vehicleCapacity; j++` of
the Bellman algorithm, entered at `j` with `m` positions left; it reads the potentials of
row `k` and improves those of row `dst` (both are row 0 in `splitSimple`, rows `k` and
`k + 1` in `splitLF`). -/
def bellman_inner (p : Params) (k dst i : Nat) : Nat → Nat → ℚ → ℚ → ℚ → Split → Split
  | 0, _, _, _, _, sp => sp
  | m + 1, j, load, distance, serviceDuration, sp =>
    if load ≤ fmul (3 / 2) p.vehicleCapacity then
      let load1 := fadd load (sp.cliSplit j).demand
      let service1 := fadd serviceDuration (sp.cliSplit j).serviceTime
      let distance1 :=
        if j = i + 1 then fadd distance (sp.cliSplit j).d0_x
        else fadd distance (sp.cliSplit (j - 1)).dnext
      let cost := route_cost p distance1 (sp.cliSplit j).dx_0 load1 service1
      let sp1 : Split :=
        if fadd (sp.potential k i) cost < sp.potential dst j then
          { sp with
            potential := upd2 sp.potential dst j (fadd (sp.potential k i) cost),
            pred := upd2 sp.pred dst j i }
        else sp
      bellman_inner p k dst i m (j + 1) load1 distance1 service1 sp1
    else sp

/-- The loop `while (queue.size() > 0 && dominatesRight(queue.get_back(), i, k))
queue.pop_back()`, with fuel for the elements of the queue. -/
def pop_back_loop (p : Params) (sp : Split) (k i : Nat) : Nat → Trivial_Deque → Trivial_Deque
  | 0, q => q
  | m + 1, q =>
    if 0 < q.size ∧ sp.dominatesRight p q.get_back i k = true then
      pop_back_loop p sp k i m q.pop_back
    else q

/-- The loop `while (queue.size() > 1 && propagate(queue.get_front(), i + 1, k) >
propagate(queue.get_next_front(), i + 1, k) - MY_EPSILON) queue.pop_front()`, with fuel for
the elements of the queue. -/
def pop_front_loop (p : Params) (sp : Split) (k i : Nat) : Nat → Trivial_Deque → Trivial_Deque
  | 0, q => q
  | m + 1, q =>
    if 1 < q.size ∧
        sp.propagate p q.get_front (i + 1) k >
          fsub (sp.propagate p q.get_next_front (i + 1) k) p.EPS
    then pop_front_loop p sp k i m q.pop_front
    else q

/-- The assignments `potential[dst][i] = propagate(queue.get_front(), i, k)` and
`pred[dst][i] = queue.get_front()` of the linear algorithm. -/
def write_front (p : Params) (k dst : Nat) (sp : Split) (q : Trivial_Deque) (i : Nat) : Split :=
  let sp1 : Split :=
    { sp with potential := upd2 sp.potential dst i (sp.propagate p q.get_front i k) }
  { sp1 with pred := upd2 sp1.pred dst i q.get_front }

/-- The update of the queue in the linear algorithm, for `i < nbClients`: `i` enters the
queue unless the back dominates it, after the elements it dominates have left; then the
fronts that are no better than their successor for `i + 1` leave. -/
def update_queue (p : Params) (k : Nat) (sp : Split) (q : Trivial_Deque) (i : Nat) :
    Trivial_Deque :=
  let q1 : Trivial_Deque :=
    if sp.dominates p q.get_back i k = false then
      (pop_back_loop p sp k i q.size.toNat q).push_back i
    else q
  pop_front_loop p sp k i q1.size.toNat q1

/-- The body of the loop over `i` of the linear algorithm; it reads the potentials of row
`k` and writes row `dst` (both are row 0 in `splitSimple`, rows `k` and `k + 1` in
`splitLF`). -/
def deque_step (p : Params) (k dst : Nat) (sp : Split) (q : Trivial_Deque) (i : Nat) :
    Split × Trivial_Deque :=
  if i < p.nbClients then
    (write_front p k dst sp q i, update_queue p k (write_front p k dst sp q i) q i)
  else (write_front p k dst sp q i, q)

/-- The loop `for i = ..; i <= nbClients && queue.size() > 0; i++` of the linear algorithm
of `splitLF`, entered at `i` with `m` positions left. In `splitSimple` the loop has no test
of the size; there the queue is never empty, see `deque_loop_simple`. -/
def deque_loop (p : Params) (k dst : Nat) : Nat → Nat → Split → Trivial_Deque → Split
  | 0, _, sp, _ => sp
  | m + 1, i, sp, q =>
    if 0 < q.size then
      deque_loop p k dst m (i + 1) (deque_step p k dst sp q i).1 (deque_step p k dst sp q i).2
    else sp

/-- The loop `for i = 1; i <= nbClients; i++` of the linear algorithm of `splitSimple`,
entered at `i` with `m` positions left. -/
def deque_loop_simple (p : Params) : Nat → Nat → Split → Trivial_Deque → Split
  | 0, _, sp, _ => sp
  | m + 1, i, sp, q =>
    deque_loop_simple p m (i + 1) (deque_step p 0 0 sp q i).1 (deque_step p 0 0 sp q i).2

/-- The loop `for i in 1 .. nbClients: potential[k][i] = 1.e30`. -/
def clear_row (p : Params) (k : Nat) (sp : Split) : Split :=
  (List.range p.nbClients).foldl
    (fun (s : Split) (m : Nat) => { s with potential := upd2 s.potential k (m + 1) INF }) sp

/-- The loop `for ii = begin; ii < end; ii++: chromR[k].push_back(chromT[ii])`, started
on the cleared route. -/
def slice (T : List Int) (b e : Nat) : List Int :=
  (List.range (e - b)).map (fun (t : Nat) => T.getD (b + t) 0)

/-- The loop `for k = nbVehicles - 1; k >= from; k--: chromR[k].clear()`. -/
def clear_routes (p : Params) (lo : Nat) (R : Nat → List Int) : Nat → List Int :=
  (List.range (p.nbVehicles - lo)).foldl
    (fun (c : Nat → List Int) (m : Nat) => upd c (p.nbVehicles - 1 - m) []) R

/-- The loop `for k = nb - 1; k >= 0; k--` that fills the routes from the predecessors,
entered with `k + 1` routes to go and the current `end`; route `k` reads row `row k` of
`pred` (row 0 in `splitSimple`, row `k + 1` in `splitLF`). Returns the routes and the last
value of `end`. -/
def fill (T : List Int) (pred : Nat → Nat → Nat) (row : Nat → Nat) :
    Nat → (Nat → List Int) → Nat → (Nat → List Int) × Nat
  | 0, R, e => (R, e)
  | k + 1, R, e => fill T pred row k (upd R k (slice T (pred (row k) e) e)) (pred (row k) e)

/-- The main algorithm of `splitSimple`: the potentials of row 0 are reinitialised, then
the Bellman or the linear algorithm runs. -/
def simple_potentials (p : Params) (sp : Split) : Split :=
  let sp1 : Split := { sp with potential := upd2 sp.potential 0 0 0 }
  let sp2 := clear_row p 0 sp1
  if p.isDurationConstraint then
    (List.range p.nbClients).foldl
      (fun (s : Split) (i : Nat) => bellman_inner p 0 0 i (p.nbClients - i) (i + 1) 0 0 0 s) sp2
  else deque_loop_simple p p.nbClients 1 sp2 (Trivial_Deque.create 0)

/-- Method `splitSimple`; the result is `none` for the `throw`, else the returned value
with the new state and individual. -/
def splitSimple (p : Params) (sp : Split) (indiv : Individual) :
    Option (Bool × Split × Individual) :=
  let sp2 := simple_potentials p sp
  if sp2.potential 0 p.nbClients > LIM then none
  else
    let R1 := clear_routes p sp2.maxVehicles.toNat indiv.chromR
    let r := fill indiv.chromT sp2.pred (fun _ => 0) sp2.maxVehicles.toNat R1 p.nbClients
    some (decide (r.2 = 0), sp2, { indiv with chromR := r.1 })

/-- The loop over `i` of one level `k` of the Bellman algorithm of `splitLF`,
`for i = k; i < nbClients && potential[k][i] < 1.e29; i++`, entered at `i` with `m`
positions left. -/
def lf_bellman_level (p : Params) (k : Nat) : Nat → Nat → Split → Split
  | 0, _, sp => sp
  | m + 1, i, sp =>
    if sp.potential k i < LIM then
      lf_bellman_level p k m (i + 1)
        (bellman_inner p k (k + 1) i (p.nbClients - i) (i + 1) 0 0 0 sp)
    else sp

/-- The main algorithm of `splitLF` for `K` vehicles: all rows `0 .. K` are reinitialised,
then the levels `0 .. K - 1` are run by the Bellman or the linear algorithm. -/
def lf_potentials (p : Params) (K : Nat) (sp : Split) : Split :=
  let sp1 : Split := { sp with potential := upd2 sp.potential 0 0 0 }
  let sp2 := (List.range (K + 1)).foldl (fun (s : Split) (k : Nat) => clear_row p k s) sp1
  if p.isDurationConstraint then
    (List.range K).foldl
      (fun (s : Split) (k : Nat) => lf_bellman_level p k (p.nbClients - k) k s) sp2
  else
    (List.range K).foldl
      (fun (s : Split) (k : Nat) =>
        deque_loop p k (k + 1) (p.nbClients - k) (k + 1) s ((Trivial_Deque.create 0).reset k))
      sp2

/-- The loop `for k = 1; k < maxVehicles; k++` of `splitLF` that looks for a cheaper number
of routes; the state is `(minCost, nbRoutes)`. -/
def best_routes (p : Params) (sp : Split) (K : Nat) : ℚ × Nat :=
  (List.range (K - 1)).foldl
    (fun (b : ℚ × Nat) (m : Nat) =>
      if sp.potential (m + 1) p.nbClients < b.1 then (sp.potential (m + 1) p.nbClients, m + 1)
      else b)
    (sp.potential K p.nbClients, K)

/-- Method `splitLF`; the result is `none` for the `throw`. -/
def splitLF (p : Params) (sp : Split) (indiv : Individual) :
    Option (Bool × Split × Individual) :=
  let K := sp.maxVehicles.toNat
  let sp2 := lf_potentials p K sp
  if sp2.potential K p.nbClients > LIM then none
  else
    let nbRoutes := (best_routes p sp2 K).2
    let R1 := clear_routes p nbRoutes indiv.chromR
    let r := fill indiv.chromT sp2.pred (fun k => k + 1) nbRoutes R1 p.nbClients
    some (decide (r.2 = 0), sp2, { indiv with chromR := r.1 })

/-- The value `std::ceil(params.totalDemand/params.vehicleCapacity)` as the argument of
`std::max<int>`: the quotient of the format, rounded up and converted to `int`; `none` when
the conversion is undefined. -/
def ceil_div (a b : ℚ) : Option Int := Dbl.toInt (Dbl.ceil (Dbl.div (Dbl.fin a) (Dbl.fin b)))

/-- Method `generalSplit(indiv, nbMaxVehicles)`, without the final call of
`evaluateCompleteCost`, which does not change the routes. -/
def generalSplit (p : Params) (sp : Split) (indiv : Individual) (nbMaxVehicles : Int) :
    Option (Split × Individual) :=
  match ceil_div p.totalDemand p.vehicleCapacity with
  | none => none
  | some lower =>
    let sp1 : Split := { sp with maxVehicles := max nbMaxVehicles lower }
    let sp2 := prepare p indiv.chromT sp1
    match splitSimple p sp2 indiv with
    | none => none
    | some (ok, sp3, indiv3) =>
      if ok then some (sp3, indiv3)
      else
        match splitLF p sp3 indiv3 with
        | none => none
        | some (_, sp4, indiv4) => some (sp4, indiv4)

end Split

/-! ### The quantities of the Split problem

For a tour `T` (the list `chromT`), position `i` of the tour is the customer `T[i - 1]`;
the routes of a split are the ranges `i + 1 .. j` of positions. The sums are those that the
source computes, rounded at each addition. -/

namespace Split

/-- The customer at position `i` of the tour, `chromT[i - 1]`. -/
def cust (T : List Int) (i : Nat) : Int := T.getD (i - 1) 0

/-- The value of `cliSplit[i]` after the first loop of `generalSplit`, for `i >= 1`. -/
def client (p : Params) (T : List Int) (i : Nat) : ClientSplit :=
  { demand := p.demand (cust T i), serviceTime := p.serviceDuration (cust T i),
    d0_x := p.timeCost 0 (cust T i), dx_0 := p.timeCost (cust T i) 0,
    dnext := if i < p.nbClients then p.timeCost (cust T i) (cust T (i + 1)) else - INF }

/-- The value of `sumLoad[i]`: the demands of the positions `1 .. i`, added one after the
other. -/
def loadTo (p : Params) (T : List Int) : Nat → ℚ
  | 0 => 0
  | i + 1 => fadd (loadTo p T i) (p.demand (cust T (i + 1)))

/-- The value of `sumService[i]`: the service times of the positions `1 .. i`, added one
after the other. -/
def servTo (p : Params) (T : List Int) : Nat → ℚ
  | 0 => 0
  | i + 1 => fadd (servTo p T i) (p.serviceDuration (cust T (i + 1)))

/-- The value of `sumDistance[i]`: the distances between consecutive positions from 1 to
`i`, added one after the other. -/
def distTo (p : Params) (T : List Int) : Nat → ℚ
  | 0 => 0
  | i + 1 => fadd (distTo p T i) (if i = 0 then 0 else (client p T i).dnext)

/-- The value of `load` in the inner loop of the Bellman algorithm for the source `i`,
after the position `j`: the demands of the positions `i + 1 .. j`, added one after the
other. -/
def loadB (p : Params) (T : List Int) (i : Nat) : Nat → ℚ
  | 0 => 0
  | j + 1 => if j + 1 ≤ i then 0 else fadd (loadB p T i j) (p.demand (cust T (j + 1)))

/-- The value of `serviceDuration` in the inner loop of the Bellman algorithm for the
source `i`, after the position `j`. -/
def servB (p : Params) (T : List Int) (i : Nat) : Nat → ℚ
  | 0 => 0
  | j + 1 => if j + 1 ≤ i then 0 else fadd (servB p T i j) (p.serviceDuration (cust T (j + 1)))

/-- The value of `distance` in the inner loop of the Bellman algorithm for the source `i`,
after the position `j`: the distance from the depot to position `i + 1` and on to position
`j`, added one after the other. -/
def distB (p : Params) (T : List Int) (i : Nat) : Nat → ℚ
  | 0 => 0
  | j + 1 =>
    if j + 1 ≤ i then 0
    else if j = i then fadd (distB p T i j) (p.timeCost 0 (cust T (j + 1)))
    else fadd (distB p T i j) (client p T j).dnext

/-- The value of `cost` in the inner loop of the Bellman algorithm for the route serving
the positions `i + 1 .. j`: its distance, the penalty of its excess load and the penalty
of its excess duration, in the arithmetic of the source. -/
def routeCost (p : Params) (T : List Int) (i j : Nat) : ℚ :=
  route_cost p (distB p T i j) (p.timeCost (cust T j) 0) (loadB p T i j) (servB p T i j)

/-- The cost of the split of the positions `i + 1 ..` into consecutive routes of the
lengths `lens`, added to `acc` route after route, as the Bellman algorithm adds the cost
of a route to the potential of its source. -/
def cutCostFrom (p : Params) (T : List Int) : ℚ → Nat → List Nat → ℚ
  | acc, _, [] => acc
  | acc, i, len :: rest =>
    cutCostFrom p T (fadd acc (routeCost p T i (i + len))) (i + len) rest

/-- The cost of the split of the positions `i + 1 ..` into consecutive routes of the
lengths `lens`. -/
def cutCost (p : Params) (T : List Int) (i : Nat) (lens : List Nat) : ℚ :=
  cutCostFrom p T 0 i lens

/-- The route serving the positions `i + 1 .. j` passes the test of the inner loop of the
Bellman algorithm at each of its positions: the load of each proper initial part of the
route is at most 1.5 times the capacity. -/
def Guarded (p : Params) (T : List Int) (i j : Nat) : Prop :=
  ∀ t, t < j → i ≤ t → loadB p T i t ≤ fmul (3 / 2) p.vehicleCapacity

instance (p : Params) (T : List Int) (i j : Nat) : Decidable (Guarded p T i j) := by
  unfold Guarded
  infer_instance

/-- The test of the inner loop holds at the positions `j - 1 .. b - 1` of a route that
starts after position `i`. -/
def GuardFrom (p : Params) (T : List Int) (i j b : Nat) : Prop :=
  ∀ t, t < b → j - 1 ≤ t → loadB p T i t ≤ fmul (3 / 2) p.vehicleCapacity

instance (p : Params) (T : List Int) (i j b : Nat) : Decidable (GuardFrom p T i j b) := by
  unfold GuardFrom
  infer_instance

/-- A split of the positions `i + 1 ..` into routes of the lengths `lens`, all positive,
each route passing the test of the Bellman algorithm. -/
def GuardedCut (p : Params) (T : List Int) : Nat → List Nat → Prop
  | _, [] => True
  | i, len :: rest => 0 < len ∧ Guarded p T i (i + len) ∧ GuardedCut p T (i + len) rest

/-- Deciding `GuardedCut`. -/
def GuardedCut.dec (p : Params) (T : List Int) : ∀ (i : Nat) (lens : List Nat),
    Decidable (GuardedCut p T i lens)
  | _, [] => isTrue trivial
  | i, len :: rest =>
    have h : Decidable (GuardedCut p T (i + len) rest) := GuardedCut.dec p T (i + len) rest
    show Decidable (0 < len ∧ Guarded p T i (i + len) ∧ GuardedCut p T (i + len) rest) from
      inferInstance

instance (p : Params) (T : List Int) (i : Nat) (lens : List Nat) :
    Decidable (GuardedCut p T i lens) := GuardedCut.dec p T i lens

/-- The value `propagate(i, j, k)` for the potential `x` of position `i`, in terms of the
tour: `x + sumDistance[j] - sumDistance[i + 1] + d0_x + dx_0 +
penaltyCapacity * max(sumLoad[j] - sumLoad[i] - vehicleCapacity, 0)`. -/
def propagateFrom (p : Params) (T : List Int) (x : ℚ) (i j : Nat) : ℚ :=
  fadd (fadd (fadd (fsub (fadd x (distTo p T j)) (distTo p T (i + 1)))
    (p.timeCost 0 (cust T (i + 1)))) (p.timeCost (cust T j) 0))
    (fmul p.penaltyCapacity (max (fsub (fsub (loadTo p T j) (loadTo p T i)) p.vehicleCapacity) 0))

/-- The test `dominates(i, j, k)` for the potentials `xi` and `xj` of the positions `i` and
`j`, in terms of the tour. -/
def dominatesFrom (p : Params) (T : List Int) (xi xj : ℚ) (i j : Nat) : Prop :=
  fadd xj (p.timeCost 0 (cust T (j + 1))) >
    fadd (fsub (fadd (fadd xi (p.timeCost 0 (cust T (i + 1)))) (distTo p T (j + 1)))
      (distTo p T (i + 1))) (fmul p.penaltyCapacity (fsub (loadTo p T j) (loadTo p T i)))

instance (p : Params) (T : List Int) (xi xj : ℚ) (i j : Nat) :
    Decidable (dominatesFrom p T xi xj i j) := by
  unfold dominatesFrom
  infer_instance

/-- The test `dominatesRight(i, j, k)` for the potentials `xi` and `xj` of the positions
`i` and `j`, in terms of the tour. -/
def dominatesRightFrom (p : Params) (T : List Int) (xi xj : ℚ) (i j : Nat) : Prop :=
  fadd xj (p.timeCost 0 (cust T (j + 1))) <
    fadd (fsub (fadd (fadd xi (p.timeCost 0 (cust T (i + 1)))) (distTo p T (j + 1)))
      (distTo p T (i + 1))) p.EPS

instance (p : Params) (T : List Int) (xi xj : ℚ) (i j : Nat) :
    Decidable (dominatesRightFrom p T xi xj i j) := by
  unfold dominatesRightFrom
  infer_instance

/-- The state of a `Split` object between two calls: the cells of index 0 of the vectors,
which no call writes, have their initial values, and every predecessor stored for a
position is at most this position. -/
structure Base (sp : Split) : Prop where
  dnext0 : (sp.cliSplit 0).dnext = 0
  load0 : sp.sumLoad 0 = 0
  serv0 : sp.sumService 0 = 0
  dist0 : sp.sumDistance 0 = 0
  pred_le : ∀ k j, sp.pred k j ≤ j

/-- The vectors filled by the first loop of `generalSplit` hold the quantities of the
tour `T`. -/
structure Prepared (p : Params) (T : List Int) (sp : Split) : Prop where
  cli : ∀ i, 1 ≤ i → i ≤ p.nbClients → sp.cliSplit i = client p T i
  load : ∀ i, i ≤ p.nbClients → sp.sumLoad i = loadTo p T i
  serv : ∀ i, i ≤ p.nbClients → sp.sumService i = servTo p T i
  dist : ∀ i, i ≤ p.nbClients → sp.sumDistance i = distTo p T i

end Split

namespace Split

/-- The costs of the splits of the first `j` positions into consecutive routes that pass
the test of the Bellman algorithm, built route after route: `Path p T j c` says that some
such split of the positions `1 .. j` has the cost `c`. -/
inductive Path (p : Params) (T : List Int) : Nat → ℚ → Prop
  | zero : Path p T 0 0
  | step {i j : Nat} {c : ℚ} : Path p T i c → i < j → j ≤ p.nbClients → Guarded p T i j →
      Path p T j (fadd c (routeCost p T i j))

/-- The cost of serving each of the first `j` positions by a route of its own. -/
def singlesTo (p : Params) (T : List Int) : Nat → ℚ
  | 0 => 0
  | j + 1 => fadd (singlesTo p T j) (routeCost p T j (j + 1))

/-- State of the Bellman algorithm of `splitSimple` when the sources `0 .. i - 1` have been
processed, started from `s0`. -/
structure BellmanInv (p : Params) (T : List Int) (s0 s : Split) (i : Nat) : Prop where
  prepared : Prepared p T s
  maxv : s.maxVehicles = s0.maxVehicles
  zero : s.potential 0 0 = 0
  rows : ∀ a b, (a ≠ 0 ∨ p.nbClients < b) →
    s.potential a b = s0.potential a b ∧ s.pred a b = s0.pred a b
  le_inf : ∀ j, 1 ≤ j → j ≤ p.nbClients → s.potential 0 j ≤ INF
  last : ∀ j, 1 ≤ j → j ≤ p.nbClients → s.potential 0 j < INF →
    s.pred 0 j < j ∧ s.pred 0 j < i ∧ Guarded p T (s.pred 0 j) j ∧
    s.potential 0 j = fadd (s.potential 0 (s.pred 0 j)) (routeCost p T (s.pred 0 j) j)
  relaxed : ∀ j, j ≤ p.nbClients → ∀ i2, i2 < i → i2 < j → Guarded p T i2 j →
    s.potential 0 j ≤ fadd (s.potential 0 i2) (routeCost p T i2 j)
  pred_le : (∀ a b, s0.pred a b ≤ b) → ∀ a b, s.pred a b ≤ b

end Split

/-- The queue is not empty and all its elements satisfy `P`. -/
def Trivial_Deque.All (q : Trivial_Deque) (P : Nat → Prop) : Prop :=
  q.indexFront ≤ q.indexBack ∧ ∀ t, q.indexFront ≤ t → t ≤ q.indexBack → P (q.myDeque t)

namespace Split

/-- The value of `end` after the filling loop has filled the routes `K - 1, .., 0` from the
initial value `e`. -/
def chain (pred : Nat → Nat → Nat) (row : Nat → Nat) : Nat → Nat → Nat
  | 0, e => e
  | K + 1, e => chain pred row K (pred (row K) e)

/-- State of the linear algorithm of `splitSimple` before the iteration of position `i`,
started from `s0`: the cells of the positions below `i` hold the value propagated from
their predecessor. -/
structure DequeInv (p : Params) (T : List Int) (s0 s : Split) (i : Nat) : Prop where
  prepared : Prepared p T s
  maxv : s.maxVehicles = s0.maxVehicles
  zero : s.potential 0 0 = 0
  rows : ∀ a b, (a ≠ 0 ∨ p.nbClients < b) →
    s.potential a b = s0.potential a b ∧ s.pred a b = s0.pred a b
  pred_zero : s.pred 0 0 = s0.pred 0 0
  pred_rest : ∀ j, i ≤ j → s.pred 0 j = s0.pred 0 j
  written : ∀ j, 1 ≤ j → j < i → s.pred 0 j < j ∧
    s.potential 0 j = propagateFrom p T (s.potential 0 (s.pred 0 j)) (s.pred 0 j) j

/-- State of level `k` of the Bellman algorithm of `splitLF` when the sources `k .. i - 1`
have been processed; `s0` is the state at the start of the level. -/
structure LevelInv (p : Params) (T : List Int) (s0 s : Split) (k i : Nat) : Prop where
  prepared : Prepared p T s
  maxv : s.maxVehicles = s0.maxVehicles
  rows : ∀ a b, (a ≠ k + 1 ∨ p.nbClients < b ∨ b = 0) →
    s.potential a b = s0.potential a b ∧ s.pred a b = s0.pred a b
  decr : ∀ b, s.potential (k + 1) b ≤ s0.potential (k + 1) b
  last : ∀ j, s.potential (k + 1) j < s0.potential (k + 1) j →
    k ≤ s.pred (k + 1) j ∧ s.pred (k + 1) j < j ∧ s.pred (k + 1) j < i ∧
    Guarded p T (s.pred (k + 1) j) j ∧
    s.potential (k + 1) j =
      fadd (s.potential k (s.pred (k + 1) j)) (routeCost p T (s.pred (k + 1) j) j) ∧
    s.potential k (s.pred (k + 1) j) < LIM
  relaxed : ∀ j, j ≤ p.nbClients → ∀ i2, k ≤ i2 → i2 < i → i2 < j → Guarded p T i2 j →
    s.potential (k + 1) j ≤ fadd (s.potential k i2) (routeCost p T i2 j)
  same : ∀ j, s.potential (k + 1) j = s0.potential (k + 1) j → s.pred (k + 1) j = s0.pred (k + 1) j

/-- State of the Bellman algorithm of `splitLF` for `K` vehicles when the levels below `k`
have been run: a potential below the sentinel in a row `1 .. k` comes from a predecessor
whose potential in the row before is below the limit, the rows above `k` hold the
sentinel. -/
structure LFDurInv (p : Params) (T : List Int) (K : Nat) (s : Split) (k : Nat) : Prop where
  prepared : Prepared p T s
  zero : s.potential 0 0 = 0
  row0 : ∀ j, 1 ≤ j → j ≤ p.nbClients → s.potential 0 j = INF
  fin : ∀ k2, 1 ≤ k2 → k2 ≤ k → ∀ j, 1 ≤ j → j ≤ p.nbClients → s.potential k2 j < INF →
    k2 - 1 ≤ s.pred k2 j ∧ s.pred k2 j < j ∧ Guarded p T (s.pred k2 j) j ∧
    s.potential k2 j =
      fadd (s.potential (k2 - 1) (s.pred k2 j)) (routeCost p T (s.pred k2 j) j) ∧
    s.potential (k2 - 1) (s.pred k2 j) < LIM
  le_inf : ∀ k2, 1 ≤ k2 → k2 ≤ K → ∀ j, 1 ≤ j → j ≤ p.nbClients → s.potential k2 j ≤ INF
  cleared : ∀ k2, k < k2 → k2 ≤ K → ∀ j, 1 ≤ j → j ≤ p.nbClients → s.potential k2 j = INF
  pred_le : ∀ a b, s.pred a b ≤ b

/-- The sentinel exceeds the costs that the linear algorithm compares it with at level 0
of `splitLF`, where the positions `i >= 1` hold the sentinel: the front 0 dominates every
such `i` in the test `dominates(0, i, 0)`. -/
def SmallL0 (p : Params) (T : List Int) : Prop :=
  ∀ i, i < p.nbClients → 1 ≤ i → dominatesFrom p T 0 INF 0 i

instance (p : Params) (T : List Int) : Decidable (SmallL0 p T) := by
  unfold SmallL0
  infer_instance

/-- State of level `k` of the linear algorithm of `splitLF` before the iteration of
position `i`; `s0` is the state at the start of the level. -/
structure LevelDq (p : Params) (T : List Int) (s0 s : Split) (k i : Nat) : Prop where
  prepared : Prepared p T s
  maxv : s.maxVehicles = s0.maxVehicles
  rows : ∀ a b, (a ≠ k + 1 ∨ b < k + 1 ∨ i ≤ b) →
    s.potential a b = s0.potential a b ∧ s.pred a b = s0.pred a b
  written : ∀ j, k + 1 ≤ j → j < i →
    k ≤ s.pred (k + 1) j ∧ s.pred (k + 1) j < j ∧ (k = 0 → s.pred (k + 1) j = 0) ∧
    s.potential (k + 1) j =
      propagateFrom p T (s.potential k (s.pred (k + 1) j)) (s.pred (k + 1) j) j

/-- State of the linear algorithm of `splitLF` for `K` vehicles when the levels below `k`
have been run: in the rows `1 .. k` the cells of the positions from the row index on hold
the value propagated from their predecessor in the row before, and the other cells of the
rows `1 .. K` hold the sentinel. -/
structure LFDqInv (p : Params) (T : List Int) (K : Nat) (s : Split) (k : Nat) : Prop where
  prepared : Prepared p T s
  zero : s.potential 0 0 = 0
  row0 : ∀ j, 1 ≤ j → j ≤ p.nbClients → s.potential 0 j = INF
  written : ∀ k2, 1 ≤ k2 → k2 ≤ k → ∀ j, k2 ≤ j → j ≤ p.nbClients →
    k2 - 1 ≤ s.pred k2 j ∧ s.pred k2 j < j ∧ (k2 = 1 → s.pred k2 j = 0) ∧
    s.potential k2 j = propagateFrom p T (s.potential (k2 - 1) (s.pred k2 j)) (s.pred k2 j) j
  cleared : ∀ k2, 1 ≤ k2 → k2 ≤ K → ∀ j, 1 ≤ j → j ≤ p.nbClients → (j < k2 ∨ k < k2) →
    s.potential k2 j = INF
  pred_le : ∀ a b, s.pred a b ≤ b

end Split

/-- An instance with three customers of demands 2, 2 and 1 and capacity 2, at distance 100
from the depot and at distance 1 from each other, with the duration constraint (the limit
is not binding); the tolerance is the value of type `double` nearest to `0.00001`. -/
def guardParams : Params :=
  { nbClients := 3, nbVehicles := 3,
    demand := fun c => if c = 0 then 0 else if c = 3 then 1 else 2,
    serviceDuration := fun _ => 0,
    timeCost := fun a b => if a = b then 0 else if a = 0 ∨ b = 0 then 100 else 1,
    vehicleCapacity := 2, durationLimit := 1000, penaltyCapacity := 1, penaltyDuration := 1,
    isDurationConstraint := true, totalDemand := 5,
    EPS := 5902958103587057 / 590295810358705651712 }

/-- The instance `guardParams` without the duration constraint. -/
def linearParams : Params := { guardParams with isDurationConstraint := false }

/-- An individual with the tour `1, 2, 3` and no routes. -/
def guardIndiv : Individual := { chromT := [1, 2, 3], chromR := fun _ => [] }

/-- An instance with one customer of demand 0, at distance 1 from the depot, and capacity
1, without duration constraint. -/
def idleParams : Params :=
  { nbClients := 1, nbVehicles := 1, demand := fun _ => 0, serviceDuration := fun _ => 0,
    timeCost := fun a b => if a = b then 0 else 1, vehicleCapacity := 1, durationLimit := 1000,
    penaltyCapacity := 1, penaltyDuration := 1, isDurationConstraint := false,
    totalDemand := 0, EPS := 5902958103587057 / 590295810358705651712 }

/-- An instance with one customer of demand 1 and capacity 1, at the distance `1.e29` from
the depot (the value of type `double` nearest to `10 ^ 29`), without duration
constraint. -/
def hugeParams : Params :=
  { nbClients := 1, nbVehicles := 1, demand := fun c => if c = 0 then 0 else 1,
    serviceDuration := fun _ => 0,
    timeCost := fun a b => if a = b then 0 else 99999999999999991433150857216,
    vehicleCapacity := 1, durationLimit := 1000, penaltyCapacity := 1, penaltyDuration := 1,
    isDurationConstraint := false, totalDemand := 1,
    EPS := 5902958103587057 / 590295810358705651712 }

/-- An instance with one customer of demand 1 and capacity 1, with the duration constraint
(the limit is not binding): the depot is at the distance `0.1` from the customer and the
customer at the distance `0.2` from the depot (the values of type `double` nearest to
`1 / 10` and `2 / 10`). -/
def tenthParams : Params :=
  { nbClients := 1, nbVehicles := 1, demand := fun c => if c = 0 then 0 else 1,
    serviceDuration := fun _ => 0,
    timeCost := fun a b => if a = b then 0 else
      if a = 0 then 3602879701896397 / 36028797018963968
      else 3602879701896397 / 18014398509481984,
    vehicleCapacity := 1, durationLimit := 1000, penaltyCapacity := 1, penaltyDuration := 1,
    isDurationConstraint := true, totalDemand := 1,
    EPS := 5902958103587057 / 590295810358705651712 }

/-! ### The linear algorithm against the Bellman recurrence -/

/-- The least of the values `f 0, .., f m`. -/
def minOver (f : Nat → ℚ) : Nat → ℚ
  | 0 => f 0
  | m + 1 => min (minOver f m) (f (m + 1))

namespace Split

/-- The quadratic Bellman recurrence of the specification, without duration constraint:
the minimum over `k < i` of `pot k` plus the distance of the route serving the positions
`k + 1 .. i` plus `penaltyCapacity * max(0, load(k + 1 .. i) - Q)`, each term computed as
the method `propagate` computes it. -/
def bellman_recurrence (p : Params) (T : List Int) (pot : Nat → ℚ) (i : Nat) : ℚ :=
  minOver (fun k => propagateFrom p T (pot k) k i) (i - 1)

end Split

/-- An instance with three customers at distance 100 from the depot, the second at the
distance `199.999994` from the two others (the value of type `double` nearest to it),
demands 10 and capacity 100, without duration constraint; the tolerance is the value of
type `double` nearest to `0.00001`. -/
def driftParams : Params :=
  { nbClients := 3, nbVehicles := 3, demand := fun c => if c = 0 then 0 else 10,
    serviceDuration := fun _ => 0,
    timeCost := fun a b => if a = b then 0 else if a = 0 ∨ b = 0 then 100 else
      if (a = 1 ∧ b = 3) ∨ (a = 3 ∧ b = 1) then 200
      else 7036874206660167 / 35184372088832,
    vehicleCapacity := 100, durationLimit := 1000, penaltyCapacity := 1, penaltyDuration := 1,
    isDurationConstraint := false, totalDemand := 30,
    EPS := 5902958103587057 / 590295810358705651712 }

namespace Split

/-- The value that the algorithms of `splitSimple` and `splitLF` give to a position `b`
reached from the position `a` of potential `x` by the route serving the positions
`a + 1 .. b`: `x + cost` in the Bellman algorithm, `propagate` in the linear algorithm. -/
def extend (p : Params) (T : List Int) (x : ℚ) (a b : Nat) : ℚ :=
  if p.isDurationConstraint then fadd x (routeCost p T a b) else propagateFrom p T x a b

end Split

namespace Split

/-- Whole loads: the tour has `nbClients` positions, the demands are whole numbers that are
not negative and sum to less than `2 ^ 51` over the tour, and the capacity is a positive
whole number below `2 ^ 51`; then the sums of demands of the source and the product
`1.5 * vehicleCapacity` are exact. -/
structure WholeLoads (p : Params) (T : List Int) : Prop where
  len : T.length = p.nbClients
  dem : ∀ c, ∃ d : Nat, p.demand c = (d : ℚ)
  sum : (T.map p.demand).sum < 2 ^ 51
  cap : ∃ q : Nat, 1 ≤ q ∧ p.vehicleCapacity = (q : ℚ) ∧ (q : ℚ) < 2 ^ 51

end Split

/-! ### The linear algorithm on whole costs -/

/-- The number `x` is whole. -/
def Whole (x : ℚ) : Prop := ∃ z : Int, x = (z : ℚ)

namespace Split

/-- The penalty `penaltyCapacity * max(x - Q, 0)` of the load `x`, in exact arithmetic. -/
def pen (p : Params) (x : ℚ) : ℚ := p.penaltyCapacity * max (x - p.vehicleCapacity) 0

/-- The part of `propagate(t, y)` that depends on the predecessor `t` only, for the
potentials `pot`, in exact arithmetic. -/
def base (p : Params) (T : List Int) (pot : Nat → ℚ) (t : Nat) : ℚ :=
  pot t + p.timeCost 0 (cust T (t + 1)) - distTo p T (t + 1)

/-- The part of `propagate(t, y)` that depends on the predecessor `t`, in exact arithmetic:
the value propagated from `t` to `y` is `hinge t y` plus a quantity of `y`. -/
def hinge (p : Params) (T : List Int) (pot : Nat → ℚ) (t y : Nat) : ℚ :=
  base p T pot t + pen p (loadTo p T y - loadTo p T t)

/-- State of the queue of the linear algorithm of `splitSimple` before the iteration of
position `i`, for the potentials `pot` and a tolerance `E`: the queue is not empty, its
elements are positions below `i` in increasing order, the bases of consecutive elements
grow by at least the tolerance and by at most the penalty of the load between them, and
every position below `i` is matched from `i` on, up to the tolerance times the number of
removals, by an element of the queue. -/
structure QueueOK (p : Params) (T : List Int) (E : ℚ) (pot : Nat → ℚ) (q : Trivial_Deque)
    (i : Nat) : Prop where
  nonempty : q.indexFront ≤ q.indexBack
  front_nonneg : 0 ≤ q.indexFront
  back_le : q.indexBack + 1 ≤ (i : Int)
  lt : ∀ u, q.indexFront ≤ u → u ≤ q.indexBack → q.myDeque u < i
  incr : ∀ u, q.indexFront ≤ u → u < q.indexBack →
    q.myDeque u < q.myDeque (u + 1) ∧
    base p T pot (q.myDeque u) + E ≤ base p T pot (q.myDeque (u + 1)) ∧
    base p T pot (q.myDeque (u + 1)) ≤ base p T pot (q.myDeque u) +
      p.penaltyCapacity * (loadTo p T (q.myDeque (u + 1)) - loadTo p T (q.myDeque u))
  cover : ∀ t, t < i → ∃ u, q.indexFront ≤ u ∧ u ≤ q.indexBack ∧
    ∀ y, i ≤ y → y ≤ p.nbClients →
      hinge p T pot (q.myDeque u) y ≤
        hinge p T pot t y + ((i : ℚ) - 1 + (q.indexFront : ℚ)) * E

/-- The front of the queue is better for position `i` than the element after it, by the
tolerance at least. -/
def FrontOK (p : Params) (T : List Int) (E : ℚ) (pot : Nat → ℚ) (q : Trivial_Deque) (i : Nat) :
    Prop :=
  q.indexFront < q.indexBack →
    hinge p T pot q.get_front i + E ≤ hinge p T pot q.get_next_front i

/-- Whole costs: the tour has `nbClients` positions; the demands, the distances, the
capacity and the penalty of the excess load are whole numbers that are not negative; `W`
is at least every distance, the capacity, the sum of the demands over the tour and the
penalty of this sum; and `(n + 3) * (n + 3) * W` is below `2 ^ 35`. Then every operation
of the linear algorithm of `splitSimple` on values of type `double` is exact. -/
structure WholeCosts (p : Params) (T : List Int) (W : Nat) : Prop where
  len : T.length = p.nbClients
  dem : ∀ c, ∃ d : Nat, p.demand c = (d : ℚ)
  dist : ∀ a b, ∃ d : Nat, p.timeCost a b = (d : ℚ) ∧ d ≤ W
  cap : ∃ q : Nat, p.vehicleCapacity = (q : ℚ) ∧ q ≤ W
  pcoef : ∃ a : Nat, p.penaltyCapacity = (a : ℚ)
  load : (T.map p.demand).sum ≤ (W : ℚ)
  penload : p.penaltyCapacity * (T.map p.demand).sum ≤ (W : ℚ)
  small : (p.nbClients + 3) * (p.nbClients + 3) * W < 2 ^ 35

end Split

namespace Split

/-- The cost of the route serving the positions `t + 1 .. y`, in exact arithmetic, as the
method `propagate` adds it to the potential of `t`: the distance of the route and the
penalty of its excess load. -/
def hop (p : Params) (T : List Int) (t y : Nat) : ℚ :=
  distTo p T y - distTo p T (t + 1) + p.timeCost 0 (cust T (t + 1)) + p.timeCost (cust T y) 0 +
    pen p (loadTo p T y - loadTo p T t)

/-- The bound `(n + 3) * W` of the cost of a route when `W` bounds the distances and the
penalty of the total load. -/
def hopBound (p : Params) (W : Nat) : ℚ := ((p.nbClients : ℚ) + 3) * (W : ℚ)

end Split

namespace Split

/-- The potentials `pot` of the positions below `i` are whole, not negative, and at most
the position times the bound of a route cost. -/
def PotOK (p : Params) (W : Nat) (pot : Nat → ℚ) (i : Nat) : Prop :=
  ∀ t, t < i → t ≤ p.nbClients → Whole (pot t) ∧ 0 ≤ pot t ∧ pot t ≤ (t : ℚ) * hopBound p W

end Split
/-! ## Lemmas on paths and cycles -/

section Paths

variable {cost : Int → Int → Int} {nx pv cc nx2 pv2 cc2 : Int → Int}

@[simp] theorem upd_same {α β : Type} [DecidableEq α] (f : α → β) (a : α) (b : β) :
    upd f a b a = b := by simp [upd]

theorem upd_other {α β : Type} [DecidableEq α] (f : α → β) (a : α) (b : β) (x : α)
    (h : x ≠ a) : upd f a b x = f x := by simp [upd, h]

theorem upd_apply {α β : Type} [DecidableEq α] (f : α → β) (a : α) (b : β) (x : α) :
    upd f a b x = if x = a then b else f x := rfl

@[simp] theorem lastFrom_nil (x : Int) : lastFrom x [] = x := rfl
@[simp] theorem lastFrom_cons (x y : Int) (l : List Int) : lastFrom x (y :: l) = lastFrom y l := rfl
@[simp] theorem initFrom_nil (x : Int) : initFrom x [] = [] := rfl
@[simp] theorem initFrom_cons (x y : Int) (l : List Int) :
    initFrom x (y :: l) = x :: initFrom y l := rfl

@[simp] theorem lastFrom_append (x : Int) (l1 l2 : List Int) :
    lastFrom x (l1 ++ l2) = lastFrom (lastFrom x l1) l2 := by
  induction l1 generalizing x with
  | nil => rfl
  | cons y t ih => simp [ih]

theorem initFrom_append_singleton (x y : Int) (l : List Int) :
    initFrom x (l ++ [y]) = x :: l := by
  induction l generalizing x with
  | nil => rfl
  | cons z t ih => simp [ih]

theorem initFrom_append_lastFrom (x : Int) (l : List Int) :
    initFrom x l ++ [lastFrom x l] = x :: l := by
  induction l generalizing x with
  | nil => rfl
  | cons z t ih => simp [ih]

theorem lastFrom_mem (x : Int) (l : List Int) : lastFrom x l ∈ x :: l := by
  induction l generalizing x with
  | nil => simp
  | cons z t ih =>
    have := ih z
    simp only [lastFrom_cons]
    exact List.mem_cons_of_mem _ this

theorem lastFrom_mem_of_ne_nil (x : Int) (l : List Int) (h : l ≠ []) : lastFrom x l ∈ l := by
  cases l with
  | nil => exact absurd rfl h
  | cons z t => exact lastFrom_mem z t

theorem initFrom_subset (x : Int) (l : List Int) : ∀ u ∈ initFrom x l, u ∈ x :: l := by
  intro u hu
  have h := initFrom_append_lastFrom x l
  have : u ∈ initFrom x l ++ [lastFrom x l] := List.mem_append_left _ hu
  rwa [h] at this

theorem lastFrom_not_mem_initFrom (x : Int) (l : List Int) (h : (x :: l).Nodup) :
    lastFrom x l ∉ initFrom x l := by
  have e := initFrom_append_lastFrom x l
  rw [← e] at h
  have := List.disjoint_of_nodup_append h
  intro hm
  exact this hm (by simp)

@[simp] theorem Seg_nil (x : Int) : Seg cost nx pv cc x [] = True := rfl

@[simp] theorem Seg_cons (x y : Int) (l : List Int) :
    Seg cost nx pv cc x (y :: l) =
      (nx x = y ∧ pv y = x ∧ cc y = cost x y ∧ Seg cost nx pv cc y l) := rfl

theorem Seg_append (x : Int) (l1 l2 : List Int) :
    Seg cost nx pv cc x (l1 ++ l2) ↔
      Seg cost nx pv cc x l1 ∧ Seg cost nx pv cc (lastFrom x l1) l2 := by
  induction l1 generalizing x with
  | nil => simp
  | cons y t ih => simp [ih, and_assoc]

/-- Frame rule: a path only reads `nx` on its vertices but the last, and `pv`, `cc` on its
vertices but the first. -/
theorem Seg_frame (x : Int) (l : List Int)
    (hn : ∀ u ∈ initFrom x l, nx2 u = nx u)
    (hp : ∀ u ∈ l, pv2 u = pv u ∧ cc2 u = cc u)
    (h : Seg cost nx pv cc x l) : Seg cost nx2 pv2 cc2 x l := by
  induction l generalizing x with
  | nil => trivial
  | cons y t ih =>
    obtain ⟨h1, h2, h3, h4⟩ := h
    refine ⟨?_, ?_, ?_, ?_⟩
    · rw [hn x (by simp)]; exact h1
    · rw [(hp y (by simp)).1]; exact h2
    · rw [(hp y (by simp)).2]; exact h3
    · exact ih y (fun u hu => hn u (by simp [hu])) (fun u hu => hp u (by simp [hu])) h4

/-- Two link structures that satisfy the same path agree on it. -/
theorem Seg_unique (x : Int) (l : List Int)
    (h : Seg cost nx pv cc x l) (h2 : Seg cost nx2 pv2 cc2 x l) :
    (∀ u ∈ initFrom x l, nx2 u = nx u) ∧ (∀ u ∈ l, pv2 u = pv u ∧ cc2 u = cc u) := by
  induction l generalizing x with
  | nil => simp
  | cons y t ih =>
    obtain ⟨a1, a2, a3, a4⟩ := h
    obtain ⟨b1, b2, b3, b4⟩ := h2
    obtain ⟨i1, i2⟩ := ih y a4 b4
    constructor
    · intro u hu
      simp only [initFrom_cons, List.mem_cons] at hu
      rcases hu with rfl | hu
      · rw [a1, b1]
      · exact i1 u hu
    · intro u hu
      simp only [List.mem_cons] at hu
      rcases hu with rfl | hu
      · exact ⟨by rw [a2, b2], by rw [a3, b3]⟩
      · exact i2 u hu

@[simp] theorem segCost_nil (x : Int) : segCost cost x [] = 0 := rfl
@[simp] theorem segCost_cons (x y : Int) (l : List Int) :
    segCost cost x (y :: l) = cost x y + segCost cost y l := rfl

theorem segCost_append (x : Int) (l1 l2 : List Int) :
    segCost cost x (l1 ++ l2) = segCost cost x l1 + segCost cost (lastFrom x l1) l2 := by
  induction l1 generalizing x with
  | nil => simp
  | cons y t ih => simp [ih, add_assoc]

theorem IsCycle_cons (x : Int) (t : List Int) :
    IsCycle cost nx pv cc (x :: t) = Seg cost nx pv cc x (t ++ [x]) := rfl

theorem cycCost_cons (x : Int) (t : List Int) :
    cycCost cost (x :: t) = segCost cost x (t ++ [x]) := rfl

theorem IsCycle_rotate_one (l : List Int) (h : IsCycle cost nx pv cc l) :
    IsCycle cost nx pv cc (l.rotate 1) := by
  cases l with
  | nil => exact h
  | cons x t =>
    cases t with
    | nil => simpa using h
    | cons y t2 =>
      have e : (x :: y :: t2).rotate 1 = y :: (t2 ++ [x]) := by simp [List.rotate_cons_succ]
      rw [e, IsCycle_cons]
      rw [IsCycle_cons] at h
      simp only [List.cons_append, Seg_cons] at h
      obtain ⟨h1, h2, h3, h4⟩ := h
      rw [Seg_append]
      refine ⟨h4, ?_⟩
      simp [h1, h2, h3]

theorem IsCycle_rotate (l : List Int) (n : Nat) (h : IsCycle cost nx pv cc l) :
    IsCycle cost nx pv cc (l.rotate n) := by
  induction n with
  | zero => simpa using h
  | succ k ih =>
    have := IsCycle_rotate_one _ ih
    rwa [List.rotate_rotate] at this

theorem IsCycle_isRotated {l l2 : List Int} (hr : l ~r l2) (h : IsCycle cost nx pv cc l) :
    IsCycle cost nx pv cc l2 := by
  obtain ⟨n, rfl⟩ := hr
  exact IsCycle_rotate l n h

theorem cycCost_rotate_one (l : List Int) : cycCost cost (l.rotate 1) = cycCost cost l := by
  cases l with
  | nil => rfl
  | cons x t =>
    cases t with
    | nil => simp
    | cons y t2 =>
      have e : (x :: y :: t2).rotate 1 = y :: (t2 ++ [x]) := by simp [List.rotate_cons_succ]
      rw [e, cycCost_cons, cycCost_cons]
      simp only [List.cons_append, segCost_cons]
      rw [segCost_append]
      simp
      ring

theorem cycCost_rotate (l : List Int) (n : Nat) : cycCost cost (l.rotate n) = cycCost cost l := by
  induction n with
  | zero => simp
  | succ k ih =>
    have := @cycCost_rotate_one cost (l.rotate k)
    rw [List.rotate_rotate] at this
    rw [this, ih]

theorem cycCost_isRotated {l l2 : List Int} (hr : l ~r l2) :
    cycCost cost l2 = cycCost cost l := by
  obtain ⟨n, rfl⟩ := hr
  exact cycCost_rotate l n

theorem exists_rotated_cons {l : List Int} {v : Int} (h : v ∈ l) :
    ∃ t, l ~r (v :: t) := by
  obtain ⟨a, b, rfl⟩ := List.append_of_mem h
  exact ⟨b ++ a, by simpa using (@List.isRotated_append _ a (v :: b))⟩

end Paths

/-! ## Field-by-field effect of the elementary assignments -/

section Projections

variable (c : Prop) [Decidable c]

@[simp] theorem CustomerNode.ite_cust_next (a b : CustomerNode) :
    (if c then a else b).next = if c then a.next else b.next := by split <;> rfl
@[simp] theorem CustomerNode.ite_cust_prev (a b : CustomerNode) :
    (if c then a else b).prev = if c then a.prev else b.prev := by split <;> rfl
@[simp] theorem CustomerNode.ite_cust_route_ptr (a b : CustomerNode) :
    (if c then a else b).route_ptr = if c then a.route_ptr else b.route_ptr := by split <;> rfl
@[simp] theorem CustomerNode.ite_cust_c_prev_curr (a b : CustomerNode) :
    (if c then a else b).c_prev_curr = if c then a.c_prev_curr else b.c_prev_curr := by split <;> rfl
@[simp] theorem CustomerNode.ite_cust_load_before (a b : CustomerNode) :
    (if c then a else b).load_before = if c then a.load_before else b.load_before := by split <;> rfl
@[simp] theorem CustomerNode.ite_cust_load_after (a b : CustomerNode) :
    (if c then a else b).load_after = if c then a.load_after else b.load_after := by split <;> rfl
@[simp] theorem RouteNode.ite_route_first_customer (a b : RouteNode) :
    (if c then a else b).first_customer = if c then a.first_customer else b.first_customer := by split <;> rfl
@[simp] theorem RouteNode.ite_route_last_customer (a b : RouteNode) :
    (if c then a else b).last_customer = if c then a.last_customer else b.last_customer := by split <;> rfl
@[simp] theorem RouteNode.ite_route_load (a b : RouteNode) :
    (if c then a else b).load = if c then a.load else b.load := by split <;> rfl
@[simp] theorem RouteNode.ite_route_next (a b : RouteNode) :
    (if c then a else b).next = if c then a.next else b.next := by split <;> rfl
@[simp] theorem RouteNode.ite_route_prev (a b : RouteNode) :
    (if c then a else b).prev = if c then a.prev else b.prev := by split <;> rfl
@[simp] theorem RouteNode.ite_route_size (a b : RouteNode) :
    (if c then a else b).size = if c then a.size else b.size := by split <;> rfl
@[simp] theorem RouteNode.ite_route_needs_cumulative_load_update (a b : RouteNode) :
    (if c then a else b).needs_cumulative_load_update = if c then a.needs_cumulative_load_update else b.needs_cumulative_load_update := by split <;> rfl
@[simp] theorem RouteNode.ite_route_in_solution (a b : RouteNode) :
    (if c then a else b).in_solution = if c then a.in_solution else b.in_solution := by split <;> rfl
@[simp] theorem RouteNode.ite_route_c_prev_curr (a b : RouteNode) :
    (if c then a else b).c_prev_curr = if c then a.c_prev_curr else b.c_prev_curr := by split <;> rfl
@[simp] theorem Solution.ite_solution_cost (a b : Solution) :
    (if c then a else b).solution_cost = if c then a.solution_cost else b.solution_cost := by split <;> rfl
@[simp] theorem Solution.ite_max_number_routes (a b : Solution) :
    (if c then a else b).max_number_routes = if c then a.max_number_routes else b.max_number_routes := by split <;> rfl
@[simp] theorem Solution.ite_routes_pool (a b : Solution) :
    (if c then a else b).routes_pool = if c then a.routes_pool else b.routes_pool := by split <;> rfl
@[simp] theorem Solution.ite_depot_node (a b : Solution) :
    (if c then a else b).depot_node = if c then a.depot_node else b.depot_node := by split <;> rfl
@[simp] theorem Solution.ite_cache (a b : Solution) :
    (if c then a else b).cache = if c then a.cache else b.cache := by split <;> rfl
@[simp] theorem Solution.ite_undo_list1 (a b : Solution) :
    (if c then a else b).undo_list1 = if c then a.undo_list1 else b.undo_list1 := by split <;> rfl
@[simp] theorem Solution.ite_do_list1 (a b : Solution) :
    (if c then a else b).do_list1 = if c then a.do_list1 else b.do_list1 := by split <;> rfl
@[simp] theorem Solution.ite_do_list2 (a b : Solution) :
    (if c then a else b).do_list2 = if c then a.do_list2 else b.do_list2 := by split <;> rfl
@[simp] theorem Solution.ite_routes_list (a b : Solution) (x : Nat) :
    (if c then a else b).routes_list x = if c then a.routes_list x else b.routes_list x := by
  split <;> rfl
@[simp] theorem Solution.ite_customers_list (a b : Solution) (x : Int) :
    (if c then a else b).customers_list x = if c then a.customers_list x else b.customers_list x := by
  split <;> rfl

end Projections

namespace Solution

section Fields

variable (s : Solution)

@[simp] theorem set_customer_next_c_next (x : Int) (v : Int) (a : Int) :
    ((s.set_customer_next x v).customers_list a).next = if a = x then v else (s.customers_list a).next := by
  simp only [set_customer_next, upd]; split <;> rfl
@[simp] theorem set_customer_next_c_prev (x : Int) (v : Int) (a : Int) :
    ((s.set_customer_next x v).customers_list a).prev = (s.customers_list a).prev := by
  simp only [set_customer_next, upd]; split <;> simp_all
@[simp] theorem set_customer_next_c_route_ptr (x : Int) (v : Int) (a : Int) :
    ((s.set_customer_next x v).customers_list a).route_ptr = (s.customers_list a).route_ptr := by
  simp only [set_customer_next, upd]; split <;> simp_all
@[simp] theorem set_customer_next_c_c_prev_curr (x : Int) (v : Int) (a : Int) :
    ((s.set_customer_next x v).customers_list a).c_prev_curr = (s.customers_list a).c_prev_curr := by
  simp only [set_customer_next, upd]; split <;> simp_all
@[simp] theorem set_customer_next_c_load_before (x : Int) (v : Int) (a : Int) :
    ((s.set_customer_next x v).customers_list a).load_before = (s.customers_list a).load_before := by
  simp only [set_customer_next, upd]; split <;> simp_all
@[simp] theorem set_customer_next_c_load_after (x : Int) (v : Int) (a : Int) :
    ((s.set_customer_next x v).customers_list a).load_after = (s.customers_list a).load_after := by
  simp only [set_customer_next, upd]; split <;> simp_all
@[simp] theorem set_customer_next_routes_list (x : Int) (v : Int) :
    (s.set_customer_next x v).routes_list = s.routes_list := rfl
@[simp] theorem set_customer_next_solution_cost (x : Int) (v : Int) :
    (s.set_customer_next x v).solution_cost = s.solution_cost := rfl
@[simp] theorem set_customer_next_max_number_routes (x : Int) (v : Int) :
    (s.set_customer_next x v).max_number_routes = s.max_number_routes := rfl
@[simp] theorem set_customer_next_routes_pool (x : Int) (v : Int) :
    (s.set_customer_next x v).routes_pool = s.routes_pool := rfl
@[simp] theorem set_customer_next_depot_node (x : Int) (v : Int) :
    (s.set_customer_next x v).depot_node = s.depot_node := rfl
@[simp] theorem set_customer_next_cache (x : Int) (v : Int) :
    (s.set_customer_next x v).cache = s.cache := rfl
@[simp] theorem set_customer_next_undo_list1 (x : Int) (v : Int) :
    (s.set_customer_next x v).undo_list1 = s.undo_list1 := rfl
@[simp] theorem set_customer_next_do_list1 (x : Int) (v : Int) :
    (s.set_customer_next x v).do_list1 = s.do_list1 := rfl
@[simp] theorem set_customer_next_do_list2 (x : Int) (v : Int) :
    (s.set_customer_next x v).do_list2 = s.do_list2 := rfl
@[simp] theorem set_customer_prev_c_next (x : Int) (v : Int) (a : Int) :
    ((s.set_customer_prev x v).customers_list a).next = (s.customers_list a).next := by
  simp only [set_customer_prev, upd]; split <;> simp_all
@[simp] theorem set_customer_prev_c_prev (x : Int) (v : Int) (a : Int) :
    ((s.set_customer_prev x v).customers_list a).prev = if a = x then v else (s.customers_list a).prev := by
  simp only [set_customer_prev, upd]; split <;> rfl
@[simp] theorem set_customer_prev_c_route_ptr (x : Int) (v : Int) (a : Int) :
    ((s.set_customer_prev x v).customers_list a).route_ptr = (s.customers_list a).route_ptr := by
  simp only [set_customer_prev, upd]; split <;> simp_all
@[simp] theorem set_customer_prev_c_c_prev_curr (x : Int) (v : Int) (a : Int) :
    ((s.set_customer_prev x v).customers_list a).c_prev_curr = (s.customers_list a).c_prev_curr := by
  simp only [set_customer_prev, upd]; split <;> simp_all
@[simp] theorem set_customer_prev_c_load_before (x : Int) (v : Int) (a : Int) :
    ((s.set_customer_prev x v).customers_list a).load_before = (s.customers_list a).load_before := by
  simp only [set_customer_prev, upd]; split <;> simp_all
@[simp] theorem set_customer_prev_c_load_after (x : Int) (v : Int) (a : Int) :
    ((s.set_customer_prev x v).customers_list a).load_after = (s.customers_list a).load_after := by
  simp only [set_customer_prev, upd]; split <;> simp_all
@[simp] theorem set_customer_prev_routes_list (x : Int) (v : Int) :
    (s.set_customer_prev x v).routes_list = s.routes_list := rfl
@[simp] theorem set_customer_prev_solution_cost (x : Int) (v : Int) :
    (s.set_customer_prev x v).solution_cost = s.solution_cost := rfl
@[simp] theorem set_customer_prev_max_number_routes (x : Int) (v : Int) :
    (s.set_customer_prev x v).max_number_routes = s.max_number_routes := rfl
@[simp] theorem set_customer_prev_routes_pool (x : Int) (v : Int) :
    (s.set_customer_prev x v).routes_pool = s.routes_pool := rfl
@[simp] theorem set_customer_prev_depot_node (x : Int) (v : Int) :
    (s.set_customer_prev x v).depot_node = s.depot_node := rfl
@[simp] theorem set_customer_prev_cache (x : Int) (v : Int) :
    (s.set_customer_prev x v).cache = s.cache := rfl
@[simp] theorem set_customer_prev_undo_list1 (x : Int) (v : Int) :
    (s.set_customer_prev x v).undo_list1 = s.undo_list1 := rfl
@[simp] theorem set_customer_prev_do_list1 (x : Int) (v : Int) :
    (s.set_customer_prev x v).do_list1 = s.do_list1 := rfl
@[simp] theorem set_customer_prev_do_list2 (x : Int) (v : Int) :
    (s.set_customer_prev x v).do_list2 = s.do_list2 := rfl
@[simp] theorem set_customer_route_ptr_c_next (x : Int) (v : Nat) (a : Int) :
    ((s.set_customer_route_ptr x v).customers_list a).next = (s.customers_list a).next := by
  simp only [set_customer_route_ptr, upd]; split <;> simp_all
@[simp] theorem set_customer_route_ptr_c_prev (x : Int) (v : Nat) (a : Int) :
    ((s.set_customer_route_ptr x v).customers_list a).prev = (s.customers_list a).prev := by
  simp only [set_customer_route_ptr, upd]; split <;> simp_all
@[simp] theorem set_customer_route_ptr_c_route_ptr (x : Int) (v : Nat) (a : Int) :
    ((s.set_customer_route_ptr x v).customers_list a).route_ptr = if a = x then v else (s.customers_list a).route_ptr := by
  simp only [set_customer_route_ptr, upd]; split <;> rfl
@[simp] theorem set_customer_route_ptr_c_c_prev_curr (x : Int) (v : Nat) (a : Int) :
    ((s.set_customer_route_ptr x v).customers_list a).c_prev_curr = (s.customers_list a).c_prev_curr := by
  simp only [set_customer_route_ptr, upd]; split <;> simp_all
@[simp] theorem set_customer_route_ptr_c_load_before (x : Int) (v : Nat) (a : Int) :
    ((s.set_customer_route_ptr x v).customers_list a).load_before = (s.customers_list a).load_before := by
  simp only [set_customer_route_ptr, upd]; split <;> simp_all
@[simp] theorem set_customer_route_ptr_c_load_after (x : Int) (v : Nat) (a : Int) :
    ((s.set_customer_route_ptr x v).customers_list a).load_after = (s.customers_list a).load_after := by
  simp only [set_customer_route_ptr, upd]; split <;> simp_all
@[simp] theorem set_customer_route_ptr_routes_list (x : Int) (v : Nat) :
    (s.set_customer_route_ptr x v).routes_list = s.routes_list := rfl
@[simp] theorem set_customer_route_ptr_solution_cost (x : Int) (v : Nat) :
    (s.set_customer_route_ptr x v).solution_cost = s.solution_cost := rfl
@[simp] theorem set_customer_route_ptr_max_number_routes (x : Int) (v : Nat) :
    (s.set_customer_route_ptr x v).max_number_routes = s.max_number_routes := rfl
@[simp] theorem set_customer_route_ptr_routes_pool (x : Int) (v : Nat) :
    (s.set_customer_route_ptr x v).routes_pool = s.routes_pool := rfl
@[simp] theorem set_customer_route_ptr_depot_node (x : Int) (v : Nat) :
    (s.set_customer_route_ptr x v).depot_node = s.depot_node := rfl
@[simp] theorem set_customer_route_ptr_cache (x : Int) (v : Nat) :
    (s.set_customer_route_ptr x v).cache = s.cache := rfl
@[simp] theorem set_customer_route_ptr_undo_list1 (x : Int) (v : Nat) :
    (s.set_customer_route_ptr x v).undo_list1 = s.undo_list1 := rfl
@[simp] theorem set_customer_route_ptr_do_list1 (x : Int) (v : Nat) :
    (s.set_customer_route_ptr x v).do_list1 = s.do_list1 := rfl
@[simp] theorem set_customer_route_ptr_do_list2 (x : Int) (v : Nat) :
    (s.set_customer_route_ptr x v).do_list2 = s.do_list2 := rfl
@[simp] theorem set_customer_c_prev_curr_c_next (x : Int) (v : Int) (a : Int) :
    ((s.set_customer_c_prev_curr x v).customers_list a).next = (s.customers_list a).next := by
  simp only [set_customer_c_prev_curr, upd]; split <;> simp_all
@[simp] theorem set_customer_c_prev_curr_c_prev (x : Int) (v : Int) (a : Int) :
    ((s.set_customer_c_prev_curr x v).customers_list a).prev = (s.customers_list a).prev := by
  simp only [set_customer_c_prev_curr, upd]; split <;> simp_all
@[simp] theorem set_customer_c_prev_curr_c_route_ptr (x : Int) (v : Int) (a : Int) :
    ((s.set_customer_c_prev_curr x v).customers_list a).route_ptr = (s.customers_list a).route_ptr := by
  simp only [set_customer_c_prev_curr, upd]; split <;> simp_all
@[simp] theorem set_customer_c_prev_curr_c_c_prev_curr (x : Int) (v : Int) (a : Int) :
    ((s.set_customer_c_prev_curr x v).customers_list a).c_prev_curr = if a = x then v else (s.customers_list a).c_prev_curr := by
  simp only [set_customer_c_prev_curr, upd]; split <;> rfl
@[simp] theorem set_customer_c_prev_curr_c_load_before (x : Int) (v : Int) (a : Int) :
    ((s.set_customer_c_prev_curr x v).customers_list a).load_before = (s.customers_list a).load_before := by
  simp only [set_customer_c_prev_curr, upd]; split <;> simp_all
@[simp] theorem set_customer_c_prev_curr_c_load_after (x : Int) (v : Int) (a : Int) :
    ((s.set_customer_c_prev_curr x v).customers_list a).load_after = (s.customers_list a).load_after := by
  simp only [set_customer_c_prev_curr, upd]; split <;> simp_all
@[simp] theorem set_customer_c_prev_curr_routes_list (x : Int) (v : Int) :
    (s.set_customer_c_prev_curr x v).routes_list = s.routes_list := rfl
@[simp] theorem set_customer_c_prev_curr_solution_cost (x : Int) (v : Int) :
    (s.set_customer_c_prev_curr x v).solution_cost = s.solution_cost := rfl
@[simp] theorem set_customer_c_prev_curr_max_number_routes (x : Int) (v : Int) :
    (s.set_customer_c_prev_curr x v).max_number_routes = s.max_number_routes := rfl
@[simp] theorem set_customer_c_prev_curr_routes_pool (x : Int) (v : Int) :
    (s.set_customer_c_prev_curr x v).routes_pool = s.routes_pool := rfl
@[simp] theorem set_customer_c_prev_curr_depot_node (x : Int) (v : Int) :
    (s.set_customer_c_prev_curr x v).depot_node = s.depot_node := rfl
@[simp] theorem set_customer_c_prev_curr_cache (x : Int) (v : Int) :
    (s.set_customer_c_prev_curr x v).cache = s.cache := rfl
@[simp] theorem set_customer_c_prev_curr_undo_list1 (x : Int) (v : Int) :
    (s.set_customer_c_prev_curr x v).undo_list1 = s.undo_list1 := rfl
@[simp] theorem set_customer_c_prev_curr_do_list1 (x : Int) (v : Int) :
    (s.set_customer_c_prev_curr x v).do_list1 = s.do_list1 := rfl
@[simp] theorem set_customer_c_prev_curr_do_list2 (x : Int) (v : Int) :
    (s.set_customer_c_prev_curr x v).do_list2 = s.do_list2 := rfl
@[simp] theorem set_customer_load_before_c_next (x : Int) (v : Int) (a : Int) :
    ((s.set_customer_load_before x v).customers_list a).next = (s.customers_list a).next := by
  simp only [set_customer_load_before, upd]; split <;> simp_all
@[simp] theorem set_customer_load_before_c_prev (x : Int) (v : Int) (a : Int) :
    ((s.set_customer_load_before x v).customers_list a).prev = (s.customers_list a).prev := by
  simp only [set_customer_load_before, upd]; split <;> simp_all
@[simp] theorem set_customer_load_before_c_route_ptr (x : Int) (v : Int) (a : Int) :
    ((s.set_customer_load_before x v).customers_list a).route_ptr = (s.customers_list a).route_ptr := by
  simp only [set_customer_load_before, upd]; split <;> simp_all
@[simp] theorem set_customer_load_before_c_c_prev_curr (x : Int) (v : Int) (a : Int) :
    ((s.set_customer_load_before x v).customers_list a).c_prev_curr = (s.customers_list a).c_prev_curr := by
  simp only [set_customer_load_before, upd]; split <;> simp_all
@[simp] theorem set_customer_load_before_c_load_before (x : Int) (v : Int) (a : Int) :
    ((s.set_customer_load_before x v).customers_list a).load_before = if a = x then v else (s.customers_list a).load_before := by
  simp only [set_customer_load_before, upd]; split <;> rfl
@[simp] theorem set_customer_load_before_c_load_after (x : Int) (v : Int) (a : Int) :
    ((s.set_customer_load_before x v).customers_list a).load_after = (s.customers_list a).load_after := by
  simp only [set_customer_load_before, upd]; split <;> simp_all
@[simp] theorem set_customer_load_before_routes_list (x : Int) (v : Int) :
    (s.set_customer_load_before x v).routes_list = s.routes_list := rfl
@[simp] theorem set_customer_load_before_solution_cost (x : Int) (v : Int) :
    (s.set_customer_load_before x v).solution_cost = s.solution_cost := rfl
@[simp] theorem set_customer_load_before_max_number_routes (x : Int) (v : Int) :
    (s.set_customer_load_before x v).max_number_routes = s.max_number_routes := rfl
@[simp] theorem set_customer_load_before_routes_pool (x : Int) (v : Int) :
    (s.set_customer_load_before x v).routes_pool = s.routes_pool := rfl
@[simp] theorem set_customer_load_before_depot_node (x : Int) (v : Int) :
    (s.set_customer_load_before x v).depot_node = s.depot_node := rfl
@[simp] theorem set_customer_load_before_cache (x : Int) (v : Int) :
    (s.set_customer_load_before x v).cache = s.cache := rfl
@[simp] theorem set_customer_load_before_undo_list1 (x : Int) (v : Int) :
    (s.set_customer_load_before x v).undo_list1 = s.undo_list1 := rfl
@[simp] theorem set_customer_load_before_do_list1 (x : Int) (v : Int) :
    (s.set_customer_load_before x v).do_list1 = s.do_list1 := rfl
@[simp] theorem set_customer_load_before_do_list2 (x : Int) (v : Int) :
    (s.set_customer_load_before x v).do_list2 = s.do_list2 := rfl
@[simp] theorem set_customer_load_after_c_next (x : Int) (v : Int) (a : Int) :
    ((s.set_customer_load_after x v).customers_list a).next = (s.customers_list a).next := by
  simp only [set_customer_load_after, upd]; split <;> simp_all
@[simp] theorem set_customer_load_after_c_prev (x : Int) (v : Int) (a : Int) :
    ((s.set_customer_load_after x v).customers_list a).prev = (s.customers_list a).prev := by
  simp only [set_customer_load_after, upd]; split <;> simp_all
@[simp] theorem set_customer_load_after_c_route_ptr (x : Int) (v : Int) (a : Int) :
    ((s.set_customer_load_after x v).customers_list a).route_ptr = (s.customers_list a).route_ptr := by
  simp only [set_customer_load_after, upd]; split <;> simp_all
@[simp] theorem set_customer_load_after_c_c_prev_curr (x : Int) (v : Int) (a : Int) :
    ((s.set_customer_load_after x v).customers_list a).c_prev_curr = (s.customers_list a).c_prev_curr := by
  simp only [set_customer_load_after, upd]; split <;> simp_all
@[simp] theorem set_customer_load_after_c_load_before (x : Int) (v : Int) (a : Int) :
    ((s.set_customer_load_after x v).customers_list a).load_before = (s.customers_list a).load_before := by
  simp only [set_customer_load_after, upd]; split <;> simp_all
@[simp] theorem set_customer_load_after_c_load_after (x : Int) (v : Int) (a : Int) :
    ((s.set_customer_load_after x v).customers_list a).load_after = if a = x then v else (s.customers_list a).load_after := by
  simp only [set_customer_load_after, upd]; split <;> rfl
@[simp] theorem set_customer_load_after_routes_list (x : Int) (v : Int) :
    (s.set_customer_load_after x v).routes_list = s.routes_list := rfl
@[simp] theorem set_customer_load_after_solution_cost (x : Int) (v : Int) :
    (s.set_customer_load_after x v).solution_cost = s.solution_cost := rfl
@[simp] theorem set_customer_load_after_max_number_routes (x : Int) (v : Int) :
    (s.set_customer_load_after x v).max_number_routes = s.max_number_routes := rfl
@[simp] theorem set_customer_load_after_routes_pool (x : Int) (v : Int) :
    (s.set_customer_load_after x v).routes_pool = s.routes_pool := rfl
@[simp] theorem set_customer_load_after_depot_node (x : Int) (v : Int) :
    (s.set_customer_load_after x v).depot_node = s.depot_node := rfl
@[simp] theorem set_customer_load_after_cache (x : Int) (v : Int) :
    (s.set_customer_load_after x v).cache = s.cache := rfl
@[simp] theorem set_customer_load_after_undo_list1 (x : Int) (v : Int) :
    (s.set_customer_load_after x v).undo_list1 = s.undo_list1 := rfl
@[simp] theorem set_customer_load_after_do_list1 (x : Int) (v : Int) :
    (s.set_customer_load_after x v).do_list1 = s.do_list1 := rfl
@[simp] theorem set_customer_load_after_do_list2 (x : Int) (v : Int) :
    (s.set_customer_load_after x v).do_list2 = s.do_list2 := rfl
@[simp] theorem set_route_first_customer_r_first_customer (r : Nat) (v : Int) (a : Nat) :
    ((s.set_route_first_customer r v).routes_list a).first_customer = if a = r then v else (s.routes_list a).first_customer := by
  simp only [set_route_first_customer, upd]; split <;> rfl
@[simp] theorem set_route_first_customer_r_last_customer (r : Nat) (v : Int) (a : Nat) :
    ((s.set_route_first_customer r v).routes_list a).last_customer = (s.routes_list a).last_customer := by
  simp only [set_route_first_customer, upd]; split <;> simp_all
@[simp] theorem set_route_first_customer_r_load (r : Nat) (v : Int) (a : Nat) :
    ((s.set_route_first_customer r v).routes_list a).load = (s.routes_list a).load := by
  simp only [set_route_first_customer, upd]; split <;> simp_all
@[simp] theorem set_route_first_customer_r_next (r : Nat) (v : Int) (a : Nat) :
    ((s.set_route_first_customer r v).routes_list a).next = (s.routes_list a).next := by
  simp only [set_route_first_customer, upd]; split <;> simp_all
@[simp] theorem set_route_first_customer_r_prev (r : Nat) (v : Int) (a : Nat) :
    ((s.set_route_first_customer r v).routes_list a).prev = (s.routes_list a).prev := by
  simp only [set_route_first_customer, upd]; split <;> simp_all
@[simp] theorem set_route_first_customer_r_size (r : Nat) (v : Int) (a : Nat) :
    ((s.set_route_first_customer r v).routes_list a).size = (s.routes_list a).size := by
  simp only [set_route_first_customer, upd]; split <;> simp_all
@[simp] theorem set_route_first_customer_r_needs_cumulative_load_update (r : Nat) (v : Int) (a : Nat) :
    ((s.set_route_first_customer r v).routes_list a).needs_cumulative_load_update = (s.routes_list a).needs_cumulative_load_update := by
  simp only [set_route_first_customer, upd]; split <;> simp_all
@[simp] theorem set_route_first_customer_r_in_solution (r : Nat) (v : Int) (a : Nat) :
    ((s.set_route_first_customer r v).routes_list a).in_solution = (s.routes_list a).in_solution := by
  simp only [set_route_first_customer, upd]; split <;> simp_all
@[simp] theorem set_route_first_customer_r_c_prev_curr (r : Nat) (v : Int) (a : Nat) :
    ((s.set_route_first_customer r v).routes_list a).c_prev_curr = (s.routes_list a).c_prev_curr := by
  simp only [set_route_first_customer, upd]; split <;> simp_all
@[simp] theorem set_route_first_customer_customers_list (r : Nat) (v : Int) :
    (s.set_route_first_customer r v).customers_list = s.customers_list := rfl
@[simp] theorem set_route_first_customer_solution_cost (r : Nat) (v : Int) :
    (s.set_route_first_customer r v).solution_cost = s.solution_cost := rfl
@[simp] theorem set_route_first_customer_max_number_routes (r : Nat) (v : Int) :
    (s.set_route_first_customer r v).max_number_routes = s.max_number_routes := rfl
@[simp] theorem set_route_first_customer_routes_pool (r : Nat) (v : Int) :
    (s.set_route_first_customer r v).routes_pool = s.routes_pool := rfl
@[simp] theorem set_route_first_customer_depot_node (r : Nat) (v : Int) :
    (s.set_route_first_customer r v).depot_node = s.depot_node := rfl
@[simp] theorem set_route_first_customer_cache (r : Nat) (v : Int) :
    (s.set_route_first_customer r v).cache = s.cache := rfl
@[simp] theorem set_route_first_customer_undo_list1 (r : Nat) (v : Int) :
    (s.set_route_first_customer r v).undo_list1 = s.undo_list1 := rfl
@[simp] theorem set_route_first_customer_do_list1 (r : Nat) (v : Int) :
    (s.set_route_first_customer r v).do_list1 = s.do_list1 := rfl
@[simp] theorem set_route_first_customer_do_list2 (r : Nat) (v : Int) :
    (s.set_route_first_customer r v).do_list2 = s.do_list2 := rfl
@[simp] theorem set_route_last_customer_r_first_customer (r : Nat) (v : Int) (a : Nat) :
    ((s.set_route_last_customer r v).routes_list a).first_customer = (s.routes_list a).first_customer := by
  simp only [set_route_last_customer, upd]; split <;> simp_all
@[simp] theorem set_route_last_customer_r_last_customer (r : Nat) (v : Int) (a : Nat) :
    ((s.set_route_last_customer r v).routes_list a).last_customer = if a = r then v else (s.routes_list a).last_customer := by
  simp only [set_route_last_customer, upd]; split <;> rfl
@[simp] theorem set_route_last_customer_r_load (r : Nat) (v : Int) (a : Nat) :
    ((s.set_route_last_customer r v).routes_list a).load = (s.routes_list a).load := by
  simp only [set_route_last_customer, upd]; split <;> simp_all
@[simp] theorem set_route_last_customer_r_next (r : Nat) (v : Int) (a : Nat) :
    ((s.set_route_last_customer r v).routes_list a).next = (s.routes_list a).next := by
  simp only [set_route_last_customer, upd]; split <;> simp_all
@[simp] theorem set_route_last_customer_r_prev (r : Nat) (v : Int) (a : Nat) :
    ((s.set_route_last_customer r v).routes_list a).prev = (s.routes_list a).prev := by
  simp only [set_route_last_customer, upd]; split <;> simp_all
@[simp] theorem set_route_last_customer_r_size (r : Nat) (v : Int) (a : Nat) :
    ((s.set_route_last_customer r v).routes_list a).size = (s.routes_list a).size := by
  simp only [set_route_last_customer, upd]; split <;> simp_all
@[simp] theorem set_route_last_customer_r_needs_cumulative_load_update (r : Nat) (v : Int) (a : Nat) :
    ((s.set_route_last_customer r v).routes_list a).needs_cumulative_load_update = (s.routes_list a).needs_cumulative_load_update := by
  simp only [set_route_last_customer, upd]; split <;> simp_all
@[simp] theorem set_route_last_customer_r_in_solution (r : Nat) (v : Int) (a : Nat) :
    ((s.set_route_last_customer r v).routes_list a).in_solution = (s.routes_list a).in_solution := by
  simp only [set_route_last_customer, upd]; split <;> simp_all
@[simp] theorem set_route_last_customer_r_c_prev_curr (r : Nat) (v : Int) (a : Nat) :
    ((s.set_route_last_customer r v).routes_list a).c_prev_curr = (s.routes_list a).c_prev_curr := by
  simp only [set_route_last_customer, upd]; split <;> simp_all
@[simp] theorem set_route_last_customer_customers_list (r : Nat) (v : Int) :
    (s.set_route_last_customer r v).customers_list = s.customers_list := rfl
@[simp] theorem set_route_last_customer_solution_cost (r : Nat) (v : Int) :
    (s.set_route_last_customer r v).solution_cost = s.solution_cost := rfl
@[simp] theorem set_route_last_customer_max_number_routes (r : Nat) (v : Int) :
    (s.set_route_last_customer r v).max_number_routes = s.max_number_routes := rfl
@[simp] theorem set_route_last_customer_routes_pool (r : Nat) (v : Int) :
    (s.set_route_last_customer r v).routes_pool = s.routes_pool := rfl
@[simp] theorem set_route_last_customer_depot_node (r : Nat) (v : Int) :
    (s.set_route_last_customer r v).depot_node = s.depot_node := rfl
@[simp] theorem set_route_last_customer_cache (r : Nat) (v : Int) :
    (s.set_route_last_customer r v).cache = s.cache := rfl
@[simp] theorem set_route_last_customer_undo_list1 (r : Nat) (v : Int) :
    (s.set_route_last_customer r v).undo_list1 = s.undo_list1 := rfl
@[simp] theorem set_route_last_customer_do_list1 (r : Nat) (v : Int) :
    (s.set_route_last_customer r v).do_list1 = s.do_list1 := rfl
@[simp] theorem set_route_last_customer_do_list2 (r : Nat) (v : Int) :
    (s.set_route_last_customer r v).do_list2 = s.do_list2 := rfl
@[simp] theorem set_route_load_r_first_customer (r : Nat) (v : Int) (a : Nat) :
    ((s.set_route_load r v).routes_list a).first_customer = (s.routes_list a).first_customer := by
  simp only [set_route_load, upd]; split <;> simp_all
@[simp] theorem set_route_load_r_last_customer (r : Nat) (v : Int) (a : Nat) :
    ((s.set_route_load r v).routes_list a).last_customer = (s.routes_list a).last_customer := by
  simp only [set_route_load, upd]; split <;> simp_all
@[simp] theorem set_route_load_r_load (r : Nat) (v : Int) (a : Nat) :
    ((s.set_route_load r v).routes_list a).load = if a = r then v else (s.routes_list a).load := by
  simp only [set_route_load, upd]; split <;> rfl
@[simp] theorem set_route_load_r_next (r : Nat) (v : Int) (a : Nat) :
    ((s.set_route_load r v).routes_list a).next = (s.routes_list a).next := by
  simp only [set_route_load, upd]; split <;> simp_all
@[simp] theorem set_route_load_r_prev (r : Nat) (v : Int) (a : Nat) :
    ((s.set_route_load r v).routes_list a).prev = (s.routes_list a).prev := by
  simp only [set_route_load, upd]; split <;> simp_all
@[simp] theorem set_route_load_r_size (r : Nat) (v : Int) (a : Nat) :
    ((s.set_route_load r v).routes_list a).size = (s.routes_list a).size := by
  simp only [set_route_load, upd]; split <;> simp_all
@[simp] theorem set_route_load_r_needs_cumulative_load_update (r : Nat) (v : Int) (a : Nat) :
    ((s.set_route_load r v).routes_list a).needs_cumulative_load_update = (s.routes_list a).needs_cumulative_load_update := by
  simp only [set_route_load, upd]; split <;> simp_all
@[simp] theorem set_route_load_r_in_solution (r : Nat) (v : Int) (a : Nat) :
    ((s.set_route_load r v).routes_list a).in_solution = (s.routes_list a).in_solution := by
  simp only [set_route_load, upd]; split <;> simp_all
@[simp] theorem set_route_load_r_c_prev_curr (r : Nat) (v : Int) (a : Nat) :
    ((s.set_route_load r v).routes_list a).c_prev_curr = (s.routes_list a).c_prev_curr := by
  simp only [set_route_load, upd]; split <;> simp_all
@[simp] theorem set_route_load_customers_list (r : Nat) (v : Int) :
    (s.set_route_load r v).customers_list = s.customers_list := rfl
@[simp] theorem set_route_load_solution_cost (r : Nat) (v : Int) :
    (s.set_route_load r v).solution_cost = s.solution_cost := rfl
@[simp] theorem set_route_load_max_number_routes (r : Nat) (v : Int) :
    (s.set_route_load r v).max_number_routes = s.max_number_routes := rfl
@[simp] theorem set_route_load_routes_pool (r : Nat) (v : Int) :
    (s.set_route_load r v).routes_pool = s.routes_pool := rfl
@[simp] theorem set_route_load_depot_node (r : Nat) (v : Int) :
    (s.set_route_load r v).depot_node = s.depot_node := rfl
@[simp] theorem set_route_load_cache (r : Nat) (v : Int) :
    (s.set_route_load r v).cache = s.cache := rfl
@[simp] theorem set_route_load_undo_list1 (r : Nat) (v : Int) :
    (s.set_route_load r v).undo_list1 = s.undo_list1 := rfl
@[simp] theorem set_route_load_do_list1 (r : Nat) (v : Int) :
    (s.set_route_load r v).do_list1 = s.do_list1 := rfl
@[simp] theorem set_route_load_do_list2 (r : Nat) (v : Int) :
    (s.set_route_load r v).do_list2 = s.do_list2 := rfl
@[simp] theorem set_route_next_r_first_customer (r : Nat) (v : Nat) (a : Nat) :
    ((s.set_route_next r v).routes_list a).first_customer = (s.routes_list a).first_customer := by
  simp only [set_route_next, upd]; split <;> simp_all
@[simp] theorem set_route_next_r_last_customer (r : Nat) (v : Nat) (a : Nat) :
    ((s.set_route_next r v).routes_list a).last_customer = (s.routes_list a).last_customer := by
  simp only [set_route_next, upd]; split <;> simp_all
@[simp] theorem set_route_next_r_load (r : Nat) (v : Nat) (a : Nat) :
    ((s.set_route_next r v).routes_list a).load = (s.routes_list a).load := by
  simp only [set_route_next, upd]; split <;> simp_all
@[simp] theorem set_route_next_r_next (r : Nat) (v : Nat) (a : Nat) :
    ((s.set_route_next r v).routes_list a).next = if a = r then v else (s.routes_list a).next := by
  simp only [set_route_next, upd]; split <;> rfl
@[simp] theorem set_route_next_r_prev (r : Nat) (v : Nat) (a : Nat) :
    ((s.set_route_next r v).routes_list a).prev = (s.routes_list a).prev := by
  simp only [set_route_next, upd]; split <;> simp_all
@[simp] theorem set_route_next_r_size (r : Nat) (v : Nat) (a : Nat) :
    ((s.set_route_next r v).routes_list a).size = (s.routes_list a).size := by
  simp only [set_route_next, upd]; split <;> simp_all
@[simp] theorem set_route_next_r_needs_cumulative_load_update (r : Nat) (v : Nat) (a : Nat) :
    ((s.set_route_next r v).routes_list a).needs_cumulative_load_update = (s.routes_list a).needs_cumulative_load_update := by
  simp only [set_route_next, upd]; split <;> simp_all
@[simp] theorem set_route_next_r_in_solution (r : Nat) (v : Nat) (a : Nat) :
    ((s.set_route_next r v).routes_list a).in_solution = (s.routes_list a).in_solution := by
  simp only [set_route_next, upd]; split <;> simp_all
@[simp] theorem set_route_next_r_c_prev_curr (r : Nat) (v : Nat) (a : Nat) :
    ((s.set_route_next r v).routes_list a).c_prev_curr = (s.routes_list a).c_prev_curr := by
  simp only [set_route_next, upd]; split <;> simp_all
@[simp] theorem set_route_next_customers_list (r : Nat) (v : Nat) :
    (s.set_route_next r v).customers_list = s.customers_list := rfl
@[simp] theorem set_route_next_solution_cost (r : Nat) (v : Nat) :
    (s.set_route_next r v).solution_cost = s.solution_cost := rfl
@[simp] theorem set_route_next_max_number_routes (r : Nat) (v : Nat) :
    (s.set_route_next r v).max_number_routes = s.max_number_routes := rfl
@[simp] theorem set_route_next_routes_pool (r : Nat) (v : Nat) :
    (s.set_route_next r v).routes_pool = s.routes_pool := rfl
@[simp] theorem set_route_next_depot_node (r : Nat) (v : Nat) :
    (s.set_route_next r v).depot_node = s.depot_node := rfl
@[simp] theorem set_route_next_cache (r : Nat) (v : Nat) :
    (s.set_route_next r v).cache = s.cache := rfl
@[simp] theorem set_route_next_undo_list1 (r : Nat) (v : Nat) :
    (s.set_route_next r v).undo_list1 = s.undo_list1 := rfl
@[simp] theorem set_route_next_do_list1 (r : Nat) (v : Nat) :
    (s.set_route_next r v).do_list1 = s.do_list1 := rfl
@[simp] theorem set_route_next_do_list2 (r : Nat) (v : Nat) :
    (s.set_route_next r v).do_list2 = s.do_list2 := rfl
@[simp] theorem set_route_prev_r_first_customer (r : Nat) (v : Nat) (a : Nat) :
    ((s.set_route_prev r v).routes_list a).first_customer = (s.routes_list a).first_customer := by
  simp only [set_route_prev, upd]; split <;> simp_all
@[simp] theorem set_route_prev_r_last_customer (r : Nat) (v : Nat) (a : Nat) :
    ((s.set_route_prev r v).routes_list a).last_customer = (s.routes_list a).last_customer := by
  simp only [set_route_prev, upd]; split <;> simp_all
@[simp] theorem set_route_prev_r_load (r : Nat) (v : Nat) (a : Nat) :
    ((s.set_route_prev r v).routes_list a).load = (s.routes_list a).load := by
  simp only [set_route_prev, upd]; split <;> simp_all
@[simp] theorem set_route_prev_r_next (r : Nat) (v : Nat) (a : Nat) :
    ((s.set_route_prev r v).routes_list a).next = (s.routes_list a).next := by
  simp only [set_route_prev, upd]; split <;> simp_all
@[simp] theorem set_route_prev_r_prev (r : Nat) (v : Nat) (a : Nat) :
    ((s.set_route_prev r v).routes_list a).prev = if a = r then v else (s.routes_list a).prev := by
  simp only [set_route_prev, upd]; split <;> rfl
@[simp] theorem set_route_prev_r_size (r : Nat) (v : Nat) (a : Nat) :
    ((s.set_route_prev r v).routes_list a).size = (s.routes_list a).size := by
  simp only [set_route_prev, upd]; split <;> simp_all
@[simp] theorem set_route_prev_r_needs_cumulative_load_update (r : Nat) (v : Nat) (a : Nat) :
    ((s.set_route_prev r v).routes_list a).needs_cumulative_load_update = (s.routes_list a).needs_cumulative_load_update := by
  simp only [set_route_prev, upd]; split <;> simp_all
@[simp] theorem set_route_prev_r_in_solution (r : Nat) (v : Nat) (a : Nat) :
    ((s.set_route_prev r v).routes_list a).in_solution = (s.routes_list a).in_solution := by
  simp only [set_route_prev, upd]; split <;> simp_all
@[simp] theorem set_route_prev_r_c_prev_curr (r : Nat) (v : Nat) (a : Nat) :
    ((s.set_route_prev r v).routes_list a).c_prev_curr = (s.routes_list a).c_prev_curr := by
  simp only [set_route_prev, upd]; split <;> simp_all
@[simp] theorem set_route_prev_customers_list (r : Nat) (v : Nat) :
    (s.set_route_prev r v).customers_list = s.customers_list := rfl
@[simp] theorem set_route_prev_solution_cost (r : Nat) (v : Nat) :
    (s.set_route_prev r v).solution_cost = s.solution_cost := rfl
@[simp] theorem set_route_prev_max_number_routes (r : Nat) (v : Nat) :
    (s.set_route_prev r v).max_number_routes = s.max_number_routes := rfl
@[simp] theorem set_route_prev_routes_pool (r : Nat) (v : Nat) :
    (s.set_route_prev r v).routes_pool = s.routes_pool := rfl
@[simp] theorem set_route_prev_depot_node (r : Nat) (v : Nat) :
    (s.set_route_prev r v).depot_node = s.depot_node := rfl
@[simp] theorem set_route_prev_cache (r : Nat) (v : Nat) :
    (s.set_route_prev r v).cache = s.cache := rfl
@[simp] theorem set_route_prev_undo_list1 (r : Nat) (v : Nat) :
    (s.set_route_prev r v).undo_list1 = s.undo_list1 := rfl
@[simp] theorem set_route_prev_do_list1 (r : Nat) (v : Nat) :
    (s.set_route_prev r v).do_list1 = s.do_list1 := rfl
@[simp] theorem set_route_prev_do_list2 (r : Nat) (v : Nat) :
    (s.set_route_prev r v).do_list2 = s.do_list2 := rfl
@[simp] theorem set_route_size_r_first_customer (r : Nat) (v : Int) (a : Nat) :
    ((s.set_route_size r v).routes_list a).first_customer = (s.routes_list a).first_customer := by
  simp only [set_route_size, upd]; split <;> simp_all
@[simp] theorem set_route_size_r_last_customer (r : Nat) (v : Int) (a : Nat) :
    ((s.set_route_size r v).routes_list a).last_customer = (s.routes_list a).last_customer := by
  simp only [set_route_size, upd]; split <;> simp_all
@[simp] theorem set_route_size_r_load (r : Nat) (v : Int) (a : Nat) :
    ((s.set_route_size r v).routes_list a).load = (s.routes_list a).load := by
  simp only [set_route_size, upd]; split <;> simp_all
@[simp] theorem set_route_size_r_next (r : Nat) (v : Int) (a : Nat) :
    ((s.set_route_size r v).routes_list a).next = (s.routes_list a).next := by
  simp only [set_route_size, upd]; split <;> simp_all
@[simp] theorem set_route_size_r_prev (r : Nat) (v : Int) (a : Nat) :
    ((s.set_route_size r v).routes_list a).prev = (s.routes_list a).prev := by
  simp only [set_route_size, upd]; split <;> simp_all
@[simp] theorem set_route_size_r_size (r : Nat) (v : Int) (a : Nat) :
    ((s.set_route_size r v).routes_list a).size = if a = r then v else (s.routes_list a).size := by
  simp only [set_route_size, upd]; split <;> rfl
@[simp] theorem set_route_size_r_needs_cumulative_load_update (r : Nat) (v : Int) (a : Nat) :
    ((s.set_route_size r v).routes_list a).needs_cumulative_load_update = (s.routes_list a).needs_cumulative_load_update := by
  simp only [set_route_size, upd]; split <;> simp_all
@[simp] theorem set_route_size_r_in_solution (r : Nat) (v : Int) (a : Nat) :
    ((s.set_route_size r v).routes_list a).in_solution = (s.routes_list a).in_solution := by
  simp only [set_route_size, upd]; split <;> simp_all
@[simp] theorem set_route_size_r_c_prev_curr (r : Nat) (v : Int) (a : Nat) :
    ((s.set_route_size r v).routes_list a).c_prev_curr = (s.routes_list a).c_prev_curr := by
  simp only [set_route_size, upd]; split <;> simp_all
@[simp] theorem set_route_size_customers_list (r : Nat) (v : Int) :
    (s.set_route_size r v).customers_list = s.customers_list := rfl
@[simp] theorem set_route_size_solution_cost (r : Nat) (v : Int) :
    (s.set_route_size r v).solution_cost = s.solution_cost := rfl
@[simp] theorem set_route_size_max_number_routes (r : Nat) (v : Int) :
    (s.set_route_size r v).max_number_routes = s.max_number_routes := rfl
@[simp] theorem set_route_size_routes_pool (r : Nat) (v : Int) :
    (s.set_route_size r v).routes_pool = s.routes_pool := rfl
@[simp] theorem set_route_size_depot_node (r : Nat) (v : Int) :
    (s.set_route_size r v).depot_node = s.depot_node := rfl
@[simp] theorem set_route_size_cache (r : Nat) (v : Int) :
    (s.set_route_size r v).cache = s.cache := rfl
@[simp] theorem set_route_size_undo_list1 (r : Nat) (v : Int) :
    (s.set_route_size r v).undo_list1 = s.undo_list1 := rfl
@[simp] theorem set_route_size_do_list1 (r : Nat) (v : Int) :
    (s.set_route_size r v).do_list1 = s.do_list1 := rfl
@[simp] theorem set_route_size_do_list2 (r : Nat) (v : Int) :
    (s.set_route_size r v).do_list2 = s.do_list2 := rfl
@[simp] theorem set_route_needs_cumulative_load_update_r_first_customer (r : Nat) (v : Bool) (a : Nat) :
    ((s.set_route_needs_cumulative_load_update r v).routes_list a).first_customer = (s.routes_list a).first_customer := by
  simp only [set_route_needs_cumulative_load_update, upd]; split <;> simp_all
@[simp] theorem set_route_needs_cumulative_load_update_r_last_customer (r : Nat) (v : Bool) (a : Nat) :
    ((s.set_route_needs_cumulative_load_update r v).routes_list a).last_customer = (s.routes_list a).last_customer := by
  simp only [set_route_needs_cumulative_load_update, upd]; split <;> simp_all
@[simp] theorem set_route_needs_cumulative_load_update_r_load (r : Nat) (v : Bool) (a : Nat) :
    ((s.set_route_needs_cumulative_load_update r v).routes_list a).load = (s.routes_list a).load := by
  simp only [set_route_needs_cumulative_load_update, upd]; split <;> simp_all
@[simp] theorem set_route_needs_cumulative_load_update_r_next (r : Nat) (v : Bool) (a : Nat) :
    ((s.set_route_needs_cumulative_load_update r v).routes_list a).next = (s.routes_list a).next := by
  simp only [set_route_needs_cumulative_load_update, upd]; split <;> simp_all
@[simp] theorem set_route_needs_cumulative_load_update_r_prev (r : Nat) (v : Bool) (a : Nat) :
    ((s.set_route_needs_cumulative_load_update r v).routes_list a).prev = (s.routes_list a).prev := by
  simp only [set_route_needs_cumulative_load_update, upd]; split <;> simp_all
@[simp] theorem set_route_needs_cumulative_load_update_r_size (r : Nat) (v : Bool) (a : Nat) :
    ((s.set_route_needs_cumulative_load_update r v).routes_list a).size = (s.routes_list a).size := by
  simp only [set_route_needs_cumulative_load_update, upd]; split <;> simp_all
@[simp] theorem set_route_needs_cumulative_load_update_r_needs_cumulative_load_update (r : Nat) (v : Bool) (a : Nat) :
    ((s.set_route_needs_cumulative_load_update r v).routes_list a).needs_cumulative_load_update = if a = r then v else (s.routes_list a).needs_cumulative_load_update := by
  simp only [set_route_needs_cumulative_load_update, upd]; split <;> rfl
@[simp] theorem set_route_needs_cumulative_load_update_r_in_solution (r : Nat) (v : Bool) (a : Nat) :
    ((s.set_route_needs_cumulative_load_update r v).routes_list a).in_solution = (s.routes_list a).in_solution := by
  simp only [set_route_needs_cumulative_load_update, upd]; split <;> simp_all
@[simp] theorem set_route_needs_cumulative_load_update_r_c_prev_curr (r : Nat) (v : Bool) (a : Nat) :
    ((s.set_route_needs_cumulative_load_update r v).routes_list a).c_prev_curr = (s.routes_list a).c_prev_curr := by
  simp only [set_route_needs_cumulative_load_update, upd]; split <;> simp_all
@[simp] theorem set_route_needs_cumulative_load_update_customers_list (r : Nat) (v : Bool) :
    (s.set_route_needs_cumulative_load_update r v).customers_list = s.customers_list := rfl
@[simp] theorem set_route_needs_cumulative_load_update_solution_cost (r : Nat) (v : Bool) :
    (s.set_route_needs_cumulative_load_update r v).solution_cost = s.solution_cost := rfl
@[simp] theorem set_route_needs_cumulative_load_update_max_number_routes (r : Nat) (v : Bool) :
    (s.set_route_needs_cumulative_load_update r v).max_number_routes = s.max_number_routes := rfl
@[simp] theorem set_route_needs_cumulative_load_update_routes_pool (r : Nat) (v : Bool) :
    (s.set_route_needs_cumulative_load_update r v).routes_pool = s.routes_pool := rfl
@[simp] theorem set_route_needs_cumulative_load_update_depot_node (r : Nat) (v : Bool) :
    (s.set_route_needs_cumulative_load_update r v).depot_node = s.depot_node := rfl
@[simp] theorem set_route_needs_cumulative_load_update_cache (r : Nat) (v : Bool) :
    (s.set_route_needs_cumulative_load_update r v).cache = s.cache := rfl
@[simp] theorem set_route_needs_cumulative_load_update_undo_list1 (r : Nat) (v : Bool) :
    (s.set_route_needs_cumulative_load_update r v).undo_list1 = s.undo_list1 := rfl
@[simp] theorem set_route_needs_cumulative_load_update_do_list1 (r : Nat) (v : Bool) :
    (s.set_route_needs_cumulative_load_update r v).do_list1 = s.do_list1 := rfl
@[simp] theorem set_route_needs_cumulative_load_update_do_list2 (r : Nat) (v : Bool) :
    (s.set_route_needs_cumulative_load_update r v).do_list2 = s.do_list2 := rfl
@[simp] theorem set_route_in_solution_r_first_customer (r : Nat) (v : Bool) (a : Nat) :
    ((s.set_route_in_solution r v).routes_list a).first_customer = (s.routes_list a).first_customer := by
  simp only [set_route_in_solution, upd]; split <;> simp_all
@[simp] theorem set_route_in_solution_r_last_customer (r : Nat) (v : Bool) (a : Nat) :
    ((s.set_route_in_solution r v).routes_list a).last_customer = (s.routes_list a).last_customer := by
  simp only [set_route_in_solution, upd]; split <;> simp_all
@[simp] theorem set_route_in_solution_r_load (r : Nat) (v : Bool) (a : Nat) :
    ((s.set_route_in_solution r v).routes_list a).load = (s.routes_list a).load := by
  simp only [set_route_in_solution, upd]; split <;> simp_all
@[simp] theorem set_route_in_solution_r_next (r : Nat) (v : Bool) (a : Nat) :
    ((s.set_route_in_solution r v).routes_list a).next = (s.routes_list a).next := by
  simp only [set_route_in_solution, upd]; split <;> simp_all
@[simp] theorem set_route_in_solution_r_prev (r : Nat) (v : Bool) (a : Nat) :
    ((s.set_route_in_solution r v).routes_list a).prev = (s.routes_list a).prev := by
  simp only [set_route_in_solution, upd]; split <;> simp_all
@[simp] theorem set_route_in_solution_r_size (r : Nat) (v : Bool) (a : Nat) :
    ((s.set_route_in_solution r v).routes_list a).size = (s.routes_list a).size := by
  simp only [set_route_in_solution, upd]; split <;> simp_all
@[simp] theorem set_route_in_solution_r_needs_cumulative_load_update (r : Nat) (v : Bool) (a : Nat) :
    ((s.set_route_in_solution r v).routes_list a).needs_cumulative_load_update = (s.routes_list a).needs_cumulative_load_update := by
  simp only [set_route_in_solution, upd]; split <;> simp_all
@[simp] theorem set_route_in_solution_r_in_solution (r : Nat) (v : Bool) (a : Nat) :
    ((s.set_route_in_solution r v).routes_list a).in_solution = if a = r then v else (s.routes_list a).in_solution := by
  simp only [set_route_in_solution, upd]; split <;> rfl
@[simp] theorem set_route_in_solution_r_c_prev_curr (r : Nat) (v : Bool) (a : Nat) :
    ((s.set_route_in_solution r v).routes_list a).c_prev_curr = (s.routes_list a).c_prev_curr := by
  simp only [set_route_in_solution, upd]; split <;> simp_all
@[simp] theorem set_route_in_solution_customers_list (r : Nat) (v : Bool) :
    (s.set_route_in_solution r v).customers_list = s.customers_list := rfl
@[simp] theorem set_route_in_solution_solution_cost (r : Nat) (v : Bool) :
    (s.set_route_in_solution r v).solution_cost = s.solution_cost := rfl
@[simp] theorem set_route_in_solution_max_number_routes (r : Nat) (v : Bool) :
    (s.set_route_in_solution r v).max_number_routes = s.max_number_routes := rfl
@[simp] theorem set_route_in_solution_routes_pool (r : Nat) (v : Bool) :
    (s.set_route_in_solution r v).routes_pool = s.routes_pool := rfl
@[simp] theorem set_route_in_solution_depot_node (r : Nat) (v : Bool) :
    (s.set_route_in_solution r v).depot_node = s.depot_node := rfl
@[simp] theorem set_route_in_solution_cache (r : Nat) (v : Bool) :
    (s.set_route_in_solution r v).cache = s.cache := rfl
@[simp] theorem set_route_in_solution_undo_list1 (r : Nat) (v : Bool) :
    (s.set_route_in_solution r v).undo_list1 = s.undo_list1 := rfl
@[simp] theorem set_route_in_solution_do_list1 (r : Nat) (v : Bool) :
    (s.set_route_in_solution r v).do_list1 = s.do_list1 := rfl
@[simp] theorem set_route_in_solution_do_list2 (r : Nat) (v : Bool) :
    (s.set_route_in_solution r v).do_list2 = s.do_list2 := rfl
@[simp] theorem set_route_c_prev_curr_r_first_customer (r : Nat) (v : Int) (a : Nat) :
    ((s.set_route_c_prev_curr r v).routes_list a).first_customer = (s.routes_list a).first_customer := by
  simp only [set_route_c_prev_curr, upd]; split <;> simp_all
@[simp] theorem set_route_c_prev_curr_r_last_customer (r : Nat) (v : Int) (a : Nat) :
    ((s.set_route_c_prev_curr r v).routes_list a).last_customer = (s.routes_list a).last_customer := by
  simp only [set_route_c_prev_curr, upd]; split <;> simp_all
@[simp] theorem set_route_c_prev_curr_r_load (r : Nat) (v : Int) (a : Nat) :
    ((s.set_route_c_prev_curr r v).routes_list a).load = (s.routes_list a).load := by
  simp only [set_route_c_prev_curr, upd]; split <;> simp_all
@[simp] theorem set_route_c_prev_curr_r_next (r : Nat) (v : Int) (a : Nat) :
    ((s.set_route_c_prev_curr r v).routes_list a).next = (s.routes_list a).next := by
  simp only [set_route_c_prev_curr, upd]; split <;> simp_all
@[simp] theorem set_route_c_prev_curr_r_prev (r : Nat) (v : Int) (a : Nat) :
    ((s.set_route_c_prev_curr r v).routes_list a).prev = (s.routes_list a).prev := by
  simp only [set_route_c_prev_curr, upd]; split <;> simp_all
@[simp] theorem set_route_c_prev_curr_r_size (r : Nat) (v : Int) (a : Nat) :
    ((s.set_route_c_prev_curr r v).routes_list a).size = (s.routes_list a).size := by
  simp only [set_route_c_prev_curr, upd]; split <;> simp_all
@[simp] theorem set_route_c_prev_curr_r_needs_cumulative_load_update (r : Nat) (v : Int) (a : Nat) :
    ((s.set_route_c_prev_curr r v).routes_list a).needs_cumulative_load_update = (s.routes_list a).needs_cumulative_load_update := by
  simp only [set_route_c_prev_curr, upd]; split <;> simp_all
@[simp] theorem set_route_c_prev_curr_r_in_solution (r : Nat) (v : Int) (a : Nat) :
    ((s.set_route_c_prev_curr r v).routes_list a).in_solution = (s.routes_list a).in_solution := by
  simp only [set_route_c_prev_curr, upd]; split <;> simp_all
@[simp] theorem set_route_c_prev_curr_r_c_prev_curr (r : Nat) (v : Int) (a : Nat) :
    ((s.set_route_c_prev_curr r v).routes_list a).c_prev_curr = if a = r then v else (s.routes_list a).c_prev_curr := by
  simp only [set_route_c_prev_curr, upd]; split <;> rfl
@[simp] theorem set_route_c_prev_curr_customers_list (r : Nat) (v : Int) :
    (s.set_route_c_prev_curr r v).customers_list = s.customers_list := rfl
@[simp] theorem set_route_c_prev_curr_solution_cost (r : Nat) (v : Int) :
    (s.set_route_c_prev_curr r v).solution_cost = s.solution_cost := rfl
@[simp] theorem set_route_c_prev_curr_max_number_routes (r : Nat) (v : Int) :
    (s.set_route_c_prev_curr r v).max_number_routes = s.max_number_routes := rfl
@[simp] theorem set_route_c_prev_curr_routes_pool (r : Nat) (v : Int) :
    (s.set_route_c_prev_curr r v).routes_pool = s.routes_pool := rfl
@[simp] theorem set_route_c_prev_curr_depot_node (r : Nat) (v : Int) :
    (s.set_route_c_prev_curr r v).depot_node = s.depot_node := rfl
@[simp] theorem set_route_c_prev_curr_cache (r : Nat) (v : Int) :
    (s.set_route_c_prev_curr r v).cache = s.cache := rfl
@[simp] theorem set_route_c_prev_curr_undo_list1 (r : Nat) (v : Int) :
    (s.set_route_c_prev_curr r v).undo_list1 = s.undo_list1 := rfl
@[simp] theorem set_route_c_prev_curr_do_list1 (r : Nat) (v : Int) :
    (s.set_route_c_prev_curr r v).do_list1 = s.do_list1 := rfl
@[simp] theorem set_route_c_prev_curr_do_list2 (r : Nat) (v : Int) :
    (s.set_route_c_prev_curr r v).do_list2 = s.do_list2 := rfl
@[simp] theorem add_cost_customers_list (d : Int) :
    (s.add_cost d).customers_list = s.customers_list := rfl
@[simp] theorem add_cost_routes_list (d : Int) :
    (s.add_cost d).routes_list = s.routes_list := rfl
@[simp] theorem add_cost_solution_cost (d : Int) :
    (s.add_cost d).solution_cost = s.solution_cost + d := rfl
@[simp] theorem add_cost_max_number_routes (d : Int) :
    (s.add_cost d).max_number_routes = s.max_number_routes := rfl
@[simp] theorem add_cost_routes_pool (d : Int) :
    (s.add_cost d).routes_pool = s.routes_pool := rfl
@[simp] theorem add_cost_depot_node (d : Int) :
    (s.add_cost d).depot_node = s.depot_node := rfl
@[simp] theorem add_cost_cache (d : Int) :
    (s.add_cost d).cache = s.cache := rfl
@[simp] theorem add_cost_undo_list1 (d : Int) :
    (s.add_cost d).undo_list1 = s.undo_list1 := rfl
@[simp] theorem add_cost_do_list1 (d : Int) :
    (s.add_cost d).do_list1 = s.do_list1 := rfl
@[simp] theorem add_cost_do_list2 (d : Int) :
    (s.add_cost d).do_list2 = s.do_list2 := rfl
@[simp] theorem cache_insert_customers_list (v : Int) :
    (s.cache_insert v).customers_list = s.customers_list := rfl
@[simp] theorem cache_insert_routes_list (v : Int) :
    (s.cache_insert v).routes_list = s.routes_list := rfl
@[simp] theorem cache_insert_solution_cost (v : Int) :
    (s.cache_insert v).solution_cost = s.solution_cost := rfl
@[simp] theorem cache_insert_max_number_routes (v : Int) :
    (s.cache_insert v).max_number_routes = s.max_number_routes := rfl
@[simp] theorem cache_insert_routes_pool (v : Int) :
    (s.cache_insert v).routes_pool = s.routes_pool := rfl
@[simp] theorem cache_insert_depot_node (v : Int) :
    (s.cache_insert v).depot_node = s.depot_node := rfl
@[simp] theorem cache_insert_cache (v : Int) :
    (s.cache_insert v).cache = s.cache.insert v := rfl
@[simp] theorem cache_insert_undo_list1 (v : Int) :
    (s.cache_insert v).undo_list1 = s.undo_list1 := rfl
@[simp] theorem cache_insert_do_list1 (v : Int) :
    (s.cache_insert v).do_list1 = s.do_list1 := rfl
@[simp] theorem cache_insert_do_list2 (v : Int) :
    (s.cache_insert v).do_list2 = s.do_list2 := rfl
@[simp] theorem set_first_route_customers_list (r : Nat) :
    (s.set_first_route r).customers_list = s.customers_list := rfl
@[simp] theorem set_first_route_routes_list (r : Nat) :
    (s.set_first_route r).routes_list = s.routes_list := rfl
@[simp] theorem set_first_route_solution_cost (r : Nat) :
    (s.set_first_route r).solution_cost = s.solution_cost := rfl
@[simp] theorem set_first_route_max_number_routes (r : Nat) :
    (s.set_first_route r).max_number_routes = s.max_number_routes := rfl
@[simp] theorem set_first_route_routes_pool (r : Nat) :
    (s.set_first_route r).routes_pool = s.routes_pool := rfl
@[simp] theorem set_first_route_depot_node (r : Nat) :
    (s.set_first_route r).depot_node = { s.depot_node with first_route := r } := rfl
@[simp] theorem set_first_route_cache (r : Nat) :
    (s.set_first_route r).cache = s.cache := rfl
@[simp] theorem set_first_route_undo_list1 (r : Nat) :
    (s.set_first_route r).undo_list1 = s.undo_list1 := rfl
@[simp] theorem set_first_route_do_list1 (r : Nat) :
    (s.set_first_route r).do_list1 = s.do_list1 := rfl
@[simp] theorem set_first_route_do_list2 (r : Nat) :
    (s.set_first_route r).do_list2 = s.do_list2 := rfl
@[simp] theorem add_num_routes_customers_list (d : Int) :
    (s.add_num_routes d).customers_list = s.customers_list := rfl
@[simp] theorem add_num_routes_routes_list (d : Int) :
    (s.add_num_routes d).routes_list = s.routes_list := rfl
@[simp] theorem add_num_routes_solution_cost (d : Int) :
    (s.add_num_routes d).solution_cost = s.solution_cost := rfl
@[simp] theorem add_num_routes_max_number_routes (d : Int) :
    (s.add_num_routes d).max_number_routes = s.max_number_routes := rfl
@[simp] theorem add_num_routes_routes_pool (d : Int) :
    (s.add_num_routes d).routes_pool = s.routes_pool := rfl
@[simp] theorem add_num_routes_depot_node (d : Int) :
    (s.add_num_routes d).depot_node = { s.depot_node with num_routes := s.depot_node.num_routes + d } := rfl
@[simp] theorem add_num_routes_cache (d : Int) :
    (s.add_num_routes d).cache = s.cache := rfl
@[simp] theorem add_num_routes_undo_list1 (d : Int) :
    (s.add_num_routes d).undo_list1 = s.undo_list1 := rfl
@[simp] theorem add_num_routes_do_list1 (d : Int) :
    (s.add_num_routes d).do_list1 = s.do_list1 := rfl
@[simp] theorem add_num_routes_do_list2 (d : Int) :
    (s.add_num_routes d).do_list2 = s.do_list2 := rfl
@[simp] theorem pool_get_customers_list :
    (s.pool_get ).customers_list = s.customers_list := rfl
@[simp] theorem pool_get_routes_list :
    (s.pool_get ).routes_list = s.routes_list := rfl
@[simp] theorem pool_get_solution_cost :
    (s.pool_get ).solution_cost = s.solution_cost := rfl
@[simp] theorem pool_get_max_number_routes :
    (s.pool_get ).max_number_routes = s.max_number_routes := rfl
@[simp] theorem pool_get_routes_pool :
    (s.pool_get ).routes_pool = s.routes_pool.get.2 := rfl
@[simp] theorem pool_get_depot_node :
    (s.pool_get ).depot_node = s.depot_node := rfl
@[simp] theorem pool_get_cache :
    (s.pool_get ).cache = s.cache := rfl
@[simp] theorem pool_get_undo_list1 :
    (s.pool_get ).undo_list1 = s.undo_list1 := rfl
@[simp] theorem pool_get_do_list1 :
    (s.pool_get ).do_list1 = s.do_list1 := rfl
@[simp] theorem pool_get_do_list2 :
    (s.pool_get ).do_list2 = s.do_list2 := rfl
@[simp] theorem pool_push_customers_list (r : Nat) :
    (s.pool_push r).customers_list = s.customers_list := rfl
@[simp] theorem pool_push_routes_list (r : Nat) :
    (s.pool_push r).routes_list = s.routes_list := rfl
@[simp] theorem pool_push_solution_cost (r : Nat) :
    (s.pool_push r).solution_cost = s.solution_cost := rfl
@[simp] theorem pool_push_max_number_routes (r : Nat) :
    (s.pool_push r).max_number_routes = s.max_number_routes := rfl
@[simp] theorem pool_push_routes_pool (r : Nat) :
    (s.pool_push r).routes_pool = s.routes_pool.push r := rfl
@[simp] theorem pool_push_depot_node (r : Nat) :
    (s.pool_push r).depot_node = s.depot_node := rfl
@[simp] theorem pool_push_cache (r : Nat) :
    (s.pool_push r).cache = s.cache := rfl
@[simp] theorem pool_push_undo_list1 (r : Nat) :
    (s.pool_push r).undo_list1 = s.undo_list1 := rfl
@[simp] theorem pool_push_do_list1 (r : Nat) :
    (s.pool_push r).do_list1 = s.do_list1 := rfl
@[simp] theorem pool_push_do_list2 (r : Nat) :
    (s.pool_push r).do_list2 = s.do_list2 := rfl
@[simp] theorem record_solution_cost (ra : Bool) (d u : Action) :
    (s.record ra d u).solution_cost = s.solution_cost := by cases ra <;> rfl
@[simp] theorem record_max_number_routes (ra : Bool) (d u : Action) :
    (s.record ra d u).max_number_routes = s.max_number_routes := by cases ra <;> rfl
@[simp] theorem record_routes_pool (ra : Bool) (d u : Action) :
    (s.record ra d u).routes_pool = s.routes_pool := by cases ra <;> rfl
@[simp] theorem record_depot_node (ra : Bool) (d u : Action) :
    (s.record ra d u).depot_node = s.depot_node := by cases ra <;> rfl
@[simp] theorem record_cache (ra : Bool) (d u : Action) :
    (s.record ra d u).cache = s.cache := by cases ra <;> rfl
@[simp] theorem record_do_list2 (ra : Bool) (d u : Action) :
    (s.record ra d u).do_list2 = s.do_list2 := by cases ra <;> rfl
@[simp] theorem record_routes_list (ra : Bool) (d u : Action) :
    (s.record ra d u).routes_list = s.routes_list := by cases ra <;> rfl
@[simp] theorem record_customers_list (ra : Bool) (d u : Action) :
    (s.record ra d u).customers_list = s.customers_list := by cases ra <;> rfl
@[simp] theorem record_do_list1 (ra : Bool) (d u : Action) :
    (s.record ra d u).do_list1 = if ra then s.do_list1 ++ [d] else s.do_list1 := by cases ra <;> rfl
@[simp] theorem record_undo_list1 (ra : Bool) (d u : Action) :
    (s.record ra d u).undo_list1 = if ra then s.undo_list1 ++ [u] else s.undo_list1 := by
  cases ra <;> rfl
@[simp] theorem set_next_vertex_ptr_c_next (r : Nat) (x y : Int) (a : Int) :
    ((s.set_next_vertex_ptr r x y).customers_list a).next =
      if x ≠ 0 ∧ a = x then y else (s.customers_list a).next := by
  unfold set_next_vertex_ptr; split <;> simp_all
@[simp] theorem set_next_vertex_ptr_c_prev (r : Nat) (x y : Int) (a : Int) :
    ((s.set_next_vertex_ptr r x y).customers_list a).prev = (s.customers_list a).prev := by
  unfold set_next_vertex_ptr; split <;> simp
@[simp] theorem set_next_vertex_ptr_c_route_ptr (r : Nat) (x y : Int) (a : Int) :
    ((s.set_next_vertex_ptr r x y).customers_list a).route_ptr = (s.customers_list a).route_ptr := by
  unfold set_next_vertex_ptr; split <;> simp
@[simp] theorem set_next_vertex_ptr_c_c_prev_curr (r : Nat) (x y : Int) (a : Int) :
    ((s.set_next_vertex_ptr r x y).customers_list a).c_prev_curr = (s.customers_list a).c_prev_curr := by
  unfold set_next_vertex_ptr; split <;> simp
@[simp] theorem set_next_vertex_ptr_c_load_before (r : Nat) (x y : Int) (a : Int) :
    ((s.set_next_vertex_ptr r x y).customers_list a).load_before = (s.customers_list a).load_before := by
  unfold set_next_vertex_ptr; split <;> simp
@[simp] theorem set_next_vertex_ptr_c_load_after (r : Nat) (x y : Int) (a : Int) :
    ((s.set_next_vertex_ptr r x y).customers_list a).load_after = (s.customers_list a).load_after := by
  unfold set_next_vertex_ptr; split <;> simp
@[simp] theorem set_next_vertex_ptr_r_first_customer (r : Nat) (x y : Int) (a : Nat) :
    ((s.set_next_vertex_ptr r x y).routes_list a).first_customer =
      if x = 0 ∧ a = r then y else (s.routes_list a).first_customer := by
  unfold set_next_vertex_ptr; split <;> simp_all
@[simp] theorem set_next_vertex_ptr_r_last_customer (r : Nat) (x y : Int) (a : Nat) :
    ((s.set_next_vertex_ptr r x y).routes_list a).last_customer = (s.routes_list a).last_customer := by
  unfold set_next_vertex_ptr; split <;> simp
@[simp] theorem set_next_vertex_ptr_r_load (r : Nat) (x y : Int) (a : Nat) :
    ((s.set_next_vertex_ptr r x y).routes_list a).load = (s.routes_list a).load := by
  unfold set_next_vertex_ptr; split <;> simp
@[simp] theorem set_next_vertex_ptr_r_next (r : Nat) (x y : Int) (a : Nat) :
    ((s.set_next_vertex_ptr r x y).routes_list a).next = (s.routes_list a).next := by
  unfold set_next_vertex_ptr; split <;> simp
@[simp] theorem set_next_vertex_ptr_r_prev (r : Nat) (x y : Int) (a : Nat) :
    ((s.set_next_vertex_ptr r x y).routes_list a).prev = (s.routes_list a).prev := by
  unfold set_next_vertex_ptr; split <;> simp
@[simp] theorem set_next_vertex_ptr_r_size (r : Nat) (x y : Int) (a : Nat) :
    ((s.set_next_vertex_ptr r x y).routes_list a).size = (s.routes_list a).size := by
  unfold set_next_vertex_ptr; split <;> simp
@[simp] theorem set_next_vertex_ptr_r_needs_cumulative_load_update (r : Nat) (x y : Int) (a : Nat) :
    ((s.set_next_vertex_ptr r x y).routes_list a).needs_cumulative_load_update = (s.routes_list a).needs_cumulative_load_update := by
  unfold set_next_vertex_ptr; split <;> simp
@[simp] theorem set_next_vertex_ptr_r_in_solution (r : Nat) (x y : Int) (a : Nat) :
    ((s.set_next_vertex_ptr r x y).routes_list a).in_solution = (s.routes_list a).in_solution := by
  unfold set_next_vertex_ptr; split <;> simp
@[simp] theorem set_next_vertex_ptr_r_c_prev_curr (r : Nat) (x y : Int) (a : Nat) :
    ((s.set_next_vertex_ptr r x y).routes_list a).c_prev_curr = (s.routes_list a).c_prev_curr := by
  unfold set_next_vertex_ptr; split <;> simp
@[simp] theorem set_next_vertex_ptr_solution_cost (r : Nat) (x y : Int) :
    (s.set_next_vertex_ptr r x y).solution_cost = s.solution_cost := by
  unfold set_next_vertex_ptr; split <;> rfl
@[simp] theorem set_next_vertex_ptr_max_number_routes (r : Nat) (x y : Int) :
    (s.set_next_vertex_ptr r x y).max_number_routes = s.max_number_routes := by
  unfold set_next_vertex_ptr; split <;> rfl
@[simp] theorem set_next_vertex_ptr_routes_pool (r : Nat) (x y : Int) :
    (s.set_next_vertex_ptr r x y).routes_pool = s.routes_pool := by
  unfold set_next_vertex_ptr; split <;> rfl
@[simp] theorem set_next_vertex_ptr_depot_node (r : Nat) (x y : Int) :
    (s.set_next_vertex_ptr r x y).depot_node = s.depot_node := by
  unfold set_next_vertex_ptr; split <;> rfl
@[simp] theorem set_next_vertex_ptr_cache (r : Nat) (x y : Int) :
    (s.set_next_vertex_ptr r x y).cache = s.cache := by
  unfold set_next_vertex_ptr; split <;> rfl
@[simp] theorem set_next_vertex_ptr_undo_list1 (r : Nat) (x y : Int) :
    (s.set_next_vertex_ptr r x y).undo_list1 = s.undo_list1 := by
  unfold set_next_vertex_ptr; split <;> rfl
@[simp] theorem set_next_vertex_ptr_do_list1 (r : Nat) (x y : Int) :
    (s.set_next_vertex_ptr r x y).do_list1 = s.do_list1 := by
  unfold set_next_vertex_ptr; split <;> rfl
@[simp] theorem set_next_vertex_ptr_do_list2 (r : Nat) (x y : Int) :
    (s.set_next_vertex_ptr r x y).do_list2 = s.do_list2 := by
  unfold set_next_vertex_ptr; split <;> rfl
@[simp] theorem set_prev_vertex_ptr_c_next (r : Nat) (x y : Int) (a : Int) :
    ((s.set_prev_vertex_ptr r x y).customers_list a).next = (s.customers_list a).next := by
  unfold set_prev_vertex_ptr; split <;> simp
@[simp] theorem set_prev_vertex_ptr_c_prev (r : Nat) (x y : Int) (a : Int) :
    ((s.set_prev_vertex_ptr r x y).customers_list a).prev =
      if x ≠ 0 ∧ a = x then y else (s.customers_list a).prev := by
  unfold set_prev_vertex_ptr; split <;> simp_all
@[simp] theorem set_prev_vertex_ptr_c_route_ptr (r : Nat) (x y : Int) (a : Int) :
    ((s.set_prev_vertex_ptr r x y).customers_list a).route_ptr = (s.customers_list a).route_ptr := by
  unfold set_prev_vertex_ptr; split <;> simp
@[simp] theorem set_prev_vertex_ptr_c_c_prev_curr (r : Nat) (x y : Int) (a : Int) :
    ((s.set_prev_vertex_ptr r x y).customers_list a).c_prev_curr = (s.customers_list a).c_prev_curr := by
  unfold set_prev_vertex_ptr; split <;> simp
@[simp] theorem set_prev_vertex_ptr_c_load_before (r : Nat) (x y : Int) (a : Int) :
    ((s.set_prev_vertex_ptr r x y).customers_list a).load_before = (s.customers_list a).load_before := by
  unfold set_prev_vertex_ptr; split <;> simp
@[simp] theorem set_prev_vertex_ptr_c_load_after (r : Nat) (x y : Int) (a : Int) :
    ((s.set_prev_vertex_ptr r x y).customers_list a).load_after = (s.customers_list a).load_after := by
  unfold set_prev_vertex_ptr; split <;> simp
@[simp] theorem set_prev_vertex_ptr_r_first_customer (r : Nat) (x y : Int) (a : Nat) :
    ((s.set_prev_vertex_ptr r x y).routes_list a).first_customer = (s.routes_list a).first_customer := by
  unfold set_prev_vertex_ptr; split <;> simp
@[simp] theorem set_prev_vertex_ptr_r_last_customer (r : Nat) (x y : Int) (a : Nat) :
    ((s.set_prev_vertex_ptr r x y).routes_list a).last_customer =
      if x = 0 ∧ a = r then y else (s.routes_list a).last_customer := by
  unfold set_prev_vertex_ptr; split <;> simp_all
@[simp] theorem set_prev_vertex_ptr_r_load (r : Nat) (x y : Int) (a : Nat) :
    ((s.set_prev_vertex_ptr r x y).routes_list a).load = (s.routes_list a).load := by
  unfold set_prev_vertex_ptr; split <;> simp
@[simp] theorem set_prev_vertex_ptr_r_next (r : Nat) (x y : Int) (a : Nat) :
    ((s.set_prev_vertex_ptr r x y).routes_list a).next = (s.routes_list a).next := by
  unfold set_prev_vertex_ptr; split <;> simp
@[simp] theorem set_prev_vertex_ptr_r_prev (r : Nat) (x y : Int) (a : Nat) :
    ((s.set_prev_vertex_ptr r x y).routes_list a).prev = (s.routes_list a).prev := by
  unfold set_prev_vertex_ptr; split <;> simp
@[simp] theorem set_prev_vertex_ptr_r_size (r : Nat) (x y : Int) (a : Nat) :
    ((s.set_prev_vertex_ptr r x y).routes_list a).size = (s.routes_list a).size := by
  unfold set_prev_vertex_ptr; split <;> simp
@[simp] theorem set_prev_vertex_ptr_r_needs_cumulative_load_update (r : Nat) (x y : Int) (a : Nat) :
    ((s.set_prev_vertex_ptr r x y).routes_list a).needs_cumulative_load_update = (s.routes_list a).needs_cumulative_load_update := by
  unfold set_prev_vertex_ptr; split <;> simp
@[simp] theorem set_prev_vertex_ptr_r_in_solution (r : Nat) (x y : Int) (a : Nat) :
    ((s.set_prev_vertex_ptr r x y).routes_list a).in_solution = (s.routes_list a).in_solution := by
  unfold set_prev_vertex_ptr; split <;> simp
@[simp] theorem set_prev_vertex_ptr_r_c_prev_curr (r : Nat) (x y : Int) (a : Nat) :
    ((s.set_prev_vertex_ptr r x y).routes_list a).c_prev_curr = (s.routes_list a).c_prev_curr := by
  unfold set_prev_vertex_ptr; split <;> simp
@[simp] theorem set_prev_vertex_ptr_solution_cost (r : Nat) (x y : Int) :
    (s.set_prev_vertex_ptr r x y).solution_cost = s.solution_cost := by
  unfold set_prev_vertex_ptr; split <;> rfl
@[simp] theorem set_prev_vertex_ptr_max_number_routes (r : Nat) (x y : Int) :
    (s.set_prev_vertex_ptr r x y).max_number_routes = s.max_number_routes := by
  unfold set_prev_vertex_ptr; split <;> rfl
@[simp] theorem set_prev_vertex_ptr_routes_pool (r : Nat) (x y : Int) :
    (s.set_prev_vertex_ptr r x y).routes_pool = s.routes_pool := by
  unfold set_prev_vertex_ptr; split <;> rfl
@[simp] theorem set_prev_vertex_ptr_depot_node (r : Nat) (x y : Int) :
    (s.set_prev_vertex_ptr r x y).depot_node = s.depot_node := by
  unfold set_prev_vertex_ptr; split <;> rfl
@[simp] theorem set_prev_vertex_ptr_cache (r : Nat) (x y : Int) :
    (s.set_prev_vertex_ptr r x y).cache = s.cache := by
  unfold set_prev_vertex_ptr; split <;> rfl
@[simp] theorem set_prev_vertex_ptr_undo_list1 (r : Nat) (x y : Int) :
    (s.set_prev_vertex_ptr r x y).undo_list1 = s.undo_list1 := by
  unfold set_prev_vertex_ptr; split <;> rfl
@[simp] theorem set_prev_vertex_ptr_do_list1 (r : Nat) (x y : Int) :
    (s.set_prev_vertex_ptr r x y).do_list1 = s.do_list1 := by
  unfold set_prev_vertex_ptr; split <;> rfl
@[simp] theorem set_prev_vertex_ptr_do_list2 (r : Nat) (x y : Int) :
    (s.set_prev_vertex_ptr r x y).do_list2 = s.do_list2 := by
  unfold set_prev_vertex_ptr; split <;> rfl
@[simp] theorem set_cost_prev_vertex_c_next (r : Nat) (x y : Int) (a : Int) :
    ((s.set_cost_prev_vertex r x y).customers_list a).next = (s.customers_list a).next := by
  unfold set_cost_prev_vertex; split <;> simp
@[simp] theorem set_cost_prev_vertex_c_prev (r : Nat) (x y : Int) (a : Int) :
    ((s.set_cost_prev_vertex r x y).customers_list a).prev = (s.customers_list a).prev := by
  unfold set_cost_prev_vertex; split <;> simp
@[simp] theorem set_cost_prev_vertex_c_route_ptr (r : Nat) (x y : Int) (a : Int) :
    ((s.set_cost_prev_vertex r x y).customers_list a).route_ptr = (s.customers_list a).route_ptr := by
  unfold set_cost_prev_vertex; split <;> simp
@[simp] theorem set_cost_prev_vertex_c_c_prev_curr (r : Nat) (x y : Int) (a : Int) :
    ((s.set_cost_prev_vertex r x y).customers_list a).c_prev_curr =
      if x ≠ 0 ∧ a = x then y else (s.customers_list a).c_prev_curr := by
  unfold set_cost_prev_vertex; split <;> simp_all
@[simp] theorem set_cost_prev_vertex_c_load_before (r : Nat) (x y : Int) (a : Int) :
    ((s.set_cost_prev_vertex r x y).customers_list a).load_before = (s.customers_list a).load_before := by
  unfold set_cost_prev_vertex; split <;> simp
@[simp] theorem set_cost_prev_vertex_c_load_after (r : Nat) (x y : Int) (a : Int) :
    ((s.set_cost_prev_vertex r x y).customers_list a).load_after = (s.customers_list a).load_after := by
  unfold set_cost_prev_vertex; split <;> simp
@[simp] theorem set_cost_prev_vertex_r_first_customer (r : Nat) (x y : Int) (a : Nat) :
    ((s.set_cost_prev_vertex r x y).routes_list a).first_customer = (s.routes_list a).first_customer := by
  unfold set_cost_prev_vertex; split <;> simp
@[simp] theorem set_cost_prev_vertex_r_last_customer (r : Nat) (x y : Int) (a : Nat) :
    ((s.set_cost_prev_vertex r x y).routes_list a).last_customer = (s.routes_list a).last_customer := by
  unfold set_cost_prev_vertex; split <;> simp
@[simp] theorem set_cost_prev_vertex_r_load (r : Nat) (x y : Int) (a : Nat) :
    ((s.set_cost_prev_vertex r x y).routes_list a).load = (s.routes_list a).load := by
  unfold set_cost_prev_vertex; split <;> simp
@[simp] theorem set_cost_prev_vertex_r_next (r : Nat) (x y : Int) (a : Nat) :
    ((s.set_cost_prev_vertex r x y).routes_list a).next = (s.routes_list a).next := by
  unfold set_cost_prev_vertex; split <;> simp
@[simp] theorem set_cost_prev_vertex_r_prev (r : Nat) (x y : Int) (a : Nat) :
    ((s.set_cost_prev_vertex r x y).routes_list a).prev = (s.routes_list a).prev := by
  unfold set_cost_prev_vertex; split <;> simp
@[simp] theorem set_cost_prev_vertex_r_size (r : Nat) (x y : Int) (a : Nat) :
    ((s.set_cost_prev_vertex r x y).routes_list a).size = (s.routes_list a).size := by
  unfold set_cost_prev_vertex; split <;> simp
@[simp] theorem set_cost_prev_vertex_r_needs_cumulative_load_update (r : Nat) (x y : Int) (a : Nat) :
    ((s.set_cost_prev_vertex r x y).routes_list a).needs_cumulative_load_update = (s.routes_list a).needs_cumulative_load_update := by
  unfold set_cost_prev_vertex; split <;> simp
@[simp] theorem set_cost_prev_vertex_r_in_solution (r : Nat) (x y : Int) (a : Nat) :
    ((s.set_cost_prev_vertex r x y).routes_list a).in_solution = (s.routes_list a).in_solution := by
  unfold set_cost_prev_vertex; split <;> simp
@[simp] theorem set_cost_prev_vertex_r_c_prev_curr (r : Nat) (x y : Int) (a : Nat) :
    ((s.set_cost_prev_vertex r x y).routes_list a).c_prev_curr =
      if x = 0 ∧ a = r then y else (s.routes_list a).c_prev_curr := by
  unfold set_cost_prev_vertex; split <;> simp_all
@[simp] theorem set_cost_prev_vertex_solution_cost (r : Nat) (x y : Int) :
    (s.set_cost_prev_vertex r x y).solution_cost = s.solution_cost := by
  unfold set_cost_prev_vertex; split <;> rfl
@[simp] theorem set_cost_prev_vertex_max_number_routes (r : Nat) (x y : Int) :
    (s.set_cost_prev_vertex r x y).max_number_routes = s.max_number_routes := by
  unfold set_cost_prev_vertex; split <;> rfl
@[simp] theorem set_cost_prev_vertex_routes_pool (r : Nat) (x y : Int) :
    (s.set_cost_prev_vertex r x y).routes_pool = s.routes_pool := by
  unfold set_cost_prev_vertex; split <;> rfl
@[simp] theorem set_cost_prev_vertex_depot_node (r : Nat) (x y : Int) :
    (s.set_cost_prev_vertex r x y).depot_node = s.depot_node := by
  unfold set_cost_prev_vertex; split <;> rfl
@[simp] theorem set_cost_prev_vertex_cache (r : Nat) (x y : Int) :
    (s.set_cost_prev_vertex r x y).cache = s.cache := by
  unfold set_cost_prev_vertex; split <;> rfl
@[simp] theorem set_cost_prev_vertex_undo_list1 (r : Nat) (x y : Int) :
    (s.set_cost_prev_vertex r x y).undo_list1 = s.undo_list1 := by
  unfold set_cost_prev_vertex; split <;> rfl
@[simp] theorem set_cost_prev_vertex_do_list1 (r : Nat) (x y : Int) :
    (s.set_cost_prev_vertex r x y).do_list1 = s.do_list1 := by
  unfold set_cost_prev_vertex; split <;> rfl
@[simp] theorem set_cost_prev_vertex_do_list2 (r : Nat) (x y : Int) :
    (s.set_cost_prev_vertex r x y).do_list2 = s.do_list2 := by
  unfold set_cost_prev_vertex; split <;> rfl

end Fields

end Solution
/-! ## Cycles: derived facts -/

section CycleFacts

variable {cost : Int → Int → Int} {nx pv cc nx2 pv2 cc2 : Int → Int}

theorem Seg_inverse (x : Int) (l : List Int) (h : Seg cost nx pv cc x l) :
    (∀ u ∈ initFrom x l, pv (nx u) = u) ∧ (∀ u ∈ l, nx (pv u) = u) := by
  induction l generalizing x with
  | nil => simp
  | cons y t ih =>
    obtain ⟨a1, a2, _, a4⟩ := h
    obtain ⟨i1, i2⟩ := ih y a4
    constructor
    · intro u hu
      simp only [initFrom_cons, List.mem_cons] at hu
      rcases hu with rfl | hu
      · rw [a1, a2]
      · exact i1 u hu
    · intro u hu
      simp only [List.mem_cons] at hu
      rcases hu with rfl | hu
      · rw [a2, a1]
      · exact i2 u hu

theorem Seg_next_mem (x : Int) (l : List Int) (h : Seg cost nx pv cc x l) :
    (∀ u ∈ initFrom x l, nx u ∈ l) ∧ (∀ u ∈ l, pv u ∈ x :: l) ∧
      (∀ u ∈ l, cc u = cost (pv u) u) := by
  induction l generalizing x with
  | nil => simp
  | cons y t ih =>
    obtain ⟨a1, a2, a3, a4⟩ := h
    obtain ⟨i1, i2, i3⟩ := ih y a4
    refine ⟨?_, ?_, ?_⟩
    · intro u hu
      simp only [initFrom_cons, List.mem_cons] at hu
      rcases hu with rfl | hu
      · rw [a1]; simp
      · exact List.mem_cons_of_mem _ (i1 u hu)
    · intro u hu
      simp only [List.mem_cons] at hu
      rcases hu with rfl | hu
      · rw [a2]; simp
      · exact List.mem_cons_of_mem _ (i2 u hu)
    · intro u hu
      simp only [List.mem_cons] at hu
      rcases hu with rfl | hu
      · rw [a3, a2]
      · exact i3 u hu

/-- On a cycle `prev` and `next` are inverse to each other, stay in the cycle, and every
cached cost is the cost of the arc from the predecessor. -/
theorem IsCycle_facts {l : List Int} (h : IsCycle cost nx pv cc l) :
    ∀ u ∈ l, pv (nx u) = u ∧ nx (pv u) = u ∧ nx u ∈ l ∧ pv u ∈ l ∧ cc u = cost (pv u) u := by
  cases l with
  | nil => exact fun u hu => absurd hu (List.not_mem_nil u)
  | cons x t =>
    rw [IsCycle_cons] at h
    obtain ⟨i1, i2⟩ := Seg_inverse x _ h
    obtain ⟨j1, j2, j3⟩ := Seg_next_mem x _ h
    rw [initFrom_append_singleton] at i1 j1
    have hm : ∀ u, u ∈ t ++ [x] ↔ u ∈ x :: t := by
      intro u; simp [or_comm]
    intro u hu
    have hu2 := (hm u).2 hu
    refine ⟨i1 u hu, i2 u hu2, (hm _).1 (j1 u hu), ?_, j3 u hu2⟩
    have := j2 u hu2
    simp only [List.mem_cons, List.mem_append, List.mem_singleton] at this ⊢
    tauto

theorem IsCycle_congr {l : List Int}
    (hc : ∀ u ∈ l, nx2 u = nx u ∧ pv2 u = pv u ∧ cc2 u = cc u)
    (h : IsCycle cost nx pv cc l) : IsCycle cost nx2 pv2 cc2 l := by
  cases l with
  | nil => exact h
  | cons x t =>
    rw [IsCycle_cons] at h ⊢
    refine Seg_frame x _ ?_ ?_ h
    · intro u hu
      rw [initFrom_append_singleton] at hu
      exact (hc u hu).1
    · intro u hu
      have : u ∈ x :: t := by
        simp only [List.mem_append, List.mem_singleton, List.mem_cons] at hu ⊢; tauto
      exact (hc u this).2

/-- Two link structures with the same cycle (up to rotation) agree on its vertices. -/
theorem IsCycle_unique {l l2 : List Int} (hr : l ~r l2)
    (h : IsCycle cost nx pv cc l) (h2 : IsCycle cost nx2 pv2 cc2 l2) :
    ∀ u ∈ l, nx2 u = nx u ∧ pv2 u = pv u ∧ cc2 u = cc u := by
  have h3 := IsCycle_isRotated hr h
  cases l2 with
  | nil => exact absurd h2 (by simp [IsCycle])
  | cons x t =>
    rw [IsCycle_cons] at h2 h3
    obtain ⟨i1, i2⟩ := Seg_unique x _ h3 h2
    rw [initFrom_append_singleton] at i1
    intro u hu
    have hu1 : u ∈ x :: t := hr.mem_iff.1 hu
    have hu2 : u ∈ t ++ [x] := by
      simp only [List.mem_append, List.mem_singleton, List.mem_cons] at hu1 ⊢; tauto
    exact ⟨i1 u hu1, i2 u hu2⟩

/-- The links of a cycle `x :: y :: t`, read at its first two vertices and at the last. -/
theorem IsCycle_head {x y : Int} {t : List Int} (h : IsCycle cost nx pv cc (x :: y :: t)) :
    nx x = y ∧ pv y = x ∧ cc y = cost x y ∧ Seg cost nx pv cc y t ∧
      nx (lastFrom y t) = x ∧ pv x = lastFrom y t ∧ cc x = cost (lastFrom y t) x := by
  rw [IsCycle_cons] at h
  simp only [List.cons_append, Seg_cons] at h
  obtain ⟨h1, h2, h3, h4⟩ := h
  rw [Seg_append] at h4
  simp only [Seg_cons, Seg_nil, and_true] at h4
  exact ⟨h1, h2, h3, h4.1, h4.2.1, h4.2.2.1, h4.2.2.2⟩

theorem IsCycle_of_head {x y : Int} {t : List Int}
    (h : nx x = y ∧ pv y = x ∧ cc y = cost x y ∧ Seg cost nx pv cc y t ∧
      nx (lastFrom y t) = x ∧ pv x = lastFrom y t ∧ cc x = cost (lastFrom y t) x) :
    IsCycle cost nx pv cc (x :: y :: t) := by
  rw [IsCycle_cons]
  simp only [List.cons_append, Seg_cons]
  obtain ⟨h1, h2, h3, h4, h5, h6, h7⟩ := h
  refine ⟨h1, h2, h3, ?_⟩
  rw [Seg_append]
  simp only [Seg_cons, Seg_nil, and_true]
  exact ⟨h4, h5, h6, h7⟩

theorem cycCost_head (x y : Int) (t : List Int) :
    cycCost cost (x :: y :: t) = cost x y + segCost cost y t + cost (lastFrom y t) x := by
  rw [cycCost_cons]
  simp only [List.cons_append, segCost_cons]
  rw [segCost_append]
  simp
  ring

theorem cycCost_single (x : Int) : cycCost cost [x] = cost x x := by
  simp [cycCost]

end CycleFacts

/-! ## Loads and sizes of vertex lists -/

theorem custs_cons (v : Int) (l : List Int) :
    custs (v :: l) = if v = 0 then custs l else v :: custs l := by
  unfold custs
  by_cases h : v = 0 <;> simp [List.filter_cons, h]

theorem loadOf_cons (I : Instance) (v : Int) (l : List Int) :
    loadOf I (v :: l) = (if v = 0 then 0 else I.demand v) + loadOf I l := by
  unfold loadOf
  rw [custs_cons]
  split <;> simp

theorem sizeOf_cons (v : Int) (l : List Int) :
    sizeOf (v :: l) = (if v = 0 then 0 else 1) + sizeOf l := by
  unfold sizeOf
  rw [custs_cons]
  split
  · simp
  · simp only [List.length_cons]; push_cast; ring

theorem custs_perm {l l2 : List Int} (h : l.Perm l2) : (custs l).Perm (custs l2) :=
  h.filter _

theorem loadOf_perm (I : Instance) {l l2 : List Int} (h : l.Perm l2) : loadOf I l = loadOf I l2 := by
  unfold loadOf
  exact ((custs_perm h).map _).sum_eq

theorem sizeOf_perm {l l2 : List Int} (h : l.Perm l2) : sizeOf l = sizeOf l2 := by
  unfold sizeOf
  rw [(custs_perm h).length_eq]

@[simp] theorem loadOf_nil (I : Instance) : loadOf I [] = 0 := rfl
@[simp] theorem sizeOf_nil : sizeOf [] = 0 := rfl

theorem loadOf_append (I : Instance) (l l2 : List Int) :
    loadOf I (l ++ l2) = loadOf I l + loadOf I l2 := by
  induction l with
  | nil => simp
  | cons x t ih => simp only [List.cons_append, loadOf_cons, ih]; ring

theorem sizeOf_append (l l2 : List Int) : sizeOf (l ++ l2) = sizeOf l + sizeOf l2 := by
  induction l with
  | nil => simp
  | cons x t ih => simp only [List.cons_append, sizeOf_cons, ih]; ring

/-! ## The representation invariant: rotation, frame and update rules -/

theorem RouteRep_isRotated {I : Instance} {s : Solution} {r : Nat} {l l2 : List Int}
    (hr : l ~r l2) (h : RouteRep I s r l) : RouteRep I s r l2 := by
  have hne : l2 ≠ [] ↔ l ≠ [] := by
    constructor
    · intro h2 h3; subst h3; exact h2 (List.isRotated_nil_iff'.1 hr).symm
    · intro h2 h3; subst h3; exact h2 (List.isRotated_nil_iff.1 hr)
  exact
    { present_iff := by rw [hne]; exact h.present_iff
      cycle := fun h2 => IsCycle_isRotated hr (h.cycle (hne.1 h2))
      nodup := hr.nodup_iff.1 h.nodup
      range := fun v hv => h.range v (hr.mem_iff.2 hv)
      mem_iff := fun v hv => by rw [← hr.mem_iff]; exact h.mem_iff v hv
      load := fun h2 => by rw [h.load (hne.1 h2)]; exact loadOf_perm I hr.perm
      size := fun h2 => by rw [h.size (hne.1 h2)]; exact sizeOf_perm hr.perm
      missing := fun h2 h0 => h.missing (hne.1 h2) (fun h3 => h0 (hr.mem_iff.1 h3)) }

theorem RouteRep_frame {I : Instance} {s s2 : Solution} {r : Nat} {l : List Int}
    (h : RouteRep I s r l)
    (hr : RouteNode.agree (s2.routes_list r) (s.routes_list r))
    (hc : ∀ u ∈ l, u ≠ 0 → CustomerNode.agree (s2.customers_list u) (s.customers_list u))
    (hm : ∀ u, u ≠ 0 → u ∉ l → (s2.customers_list u).route_ptr = r → r = 0) :
    RouteRep I s2 r l := by
  obtain ⟨r1, r2, r3, r4, r5, r6⟩ := hr
  have hg : ∀ u ∈ l, s2.get_next_vertex r u = s.get_next_vertex r u ∧
      s2.get_prev_vertex r u = s.get_prev_vertex r u ∧
      s2.get_cost_prev_vertex r u = s.get_cost_prev_vertex r u := by
    intro u hu
    by_cases h0 : u = 0
    · subst h0
      simp [Solution.get_next_vertex, Solution.get_prev_vertex, Solution.get_cost_prev_vertex,
        r1, r2, r6]
    · obtain ⟨c1, c2, _, c4⟩ := hc u hu h0
      simp [Solution.get_next_vertex, Solution.get_prev_vertex, Solution.get_cost_prev_vertex,
        h0, c1, c2, c4]
  exact
    { present_iff := by rw [r5]; exact h.present_iff
      cycle := fun h2 => IsCycle_congr hg (h.cycle h2)
      nodup := h.nodup
      range := h.range
      mem_iff := fun v hv => by
        constructor
        · intro hin
          rw [(hc v hin hv).2.2.1]
          exact (h.mem_iff v hv).1 hin
        · rintro ⟨h1, h2⟩
          by_contra hin
          exact h2 (hm v hv hin h1)
      load := fun h2 => by rw [r3]; exact h.load h2
      size := fun h2 => by rw [r4]; exact h.size h2
      missing := fun h2 h0 => by rw [r1, r2]; exact h.missing h2 h0 }

theorem Rep.not_mem_of_ne {I : Instance} {s : Solution} {A : Nat → List Int} (hR : Rep I s A)
    {r r2 : Nat} (hr : r2 ≠ r) {u : Int} (hu : u ≠ 0) (h : u ∈ A r) : u ∉ A r2 := by
  intro h2
  have a := ((hR.routes r).mem_iff u hu).1 h
  have b := ((hR.routes r2).mem_iff u hu).1 h2
  exact hr (b.1.symm.trans a.1)

theorem Rep.zero_absent {I : Instance} {s : Solution} {A : Nat → List Int} (hR : Rep I s A) :
    A 0 = [] := by
  by_contra h
  have := (hR.bound 0 h).1
  omega

/-- When a route is in the solution the pool is not full, so that `push` stays within the
array (`assert(begin >= 0)` of `FixedSizeValueStack::push`): the items of the pool are
distinct absent routes among `1 .. max_number_routes - 1`. -/
theorem Rep.pool_begin_pos {I : Instance} {s : Solution} {A : Nat → List Int} (hR : Rep I s A)
    {r : Nat} (hr : A r ≠ []) : 0 < s.routes_pool.begin := by
  by_contra hneg
  have hb : s.routes_pool.begin ≤ 0 := not_lt.1 hneg
  obtain ⟨hr1, hr2⟩ := hR.bound r hr
  have hcap := hR.pool_cap
  obtain ⟨n, hn⟩ : ∃ n, s.max_number_routes = n + 1 := ⟨s.max_number_routes - 1, by omega⟩
  have hcap2 : s.routes_pool.capacity = (n : Int) := by rw [hcap, hn]; push_cast; ring
  have hmaps : ∀ k ∈ Finset.range n,
      s.routes_pool.array (k : Int) ∈ ((Finset.range (n + 1)).erase 0).erase r := by
    intro k hk
    have hk2 := Finset.mem_range.1 hk
    obtain ⟨a, b, c⟩ := hR.pool_absent (k : Int) (by omega) (by rw [hcap2]; exact_mod_cast hk2)
    refine Finset.mem_erase.2 ⟨fun e => hr (e ▸ a), Finset.mem_erase.2 ⟨?_, ?_⟩⟩
    · omega
    · exact Finset.mem_range.2 (by omega)
  have hinj : Set.InjOn (fun k : Nat => s.routes_pool.array (k : Int)) (Finset.range n) := by
    intro k hk j hj e
    have hk2 := Finset.mem_range.1 (Finset.mem_coe.1 hk)
    have hj2 := Finset.mem_range.1 (Finset.mem_coe.1 hj)
    have := hR.pool_inj (k : Int) (j : Int) (by omega) (by rw [hcap2]; exact_mod_cast hk2)
      (by omega) (by rw [hcap2]; exact_mod_cast hj2) e
    exact_mod_cast this
  have hcard := Finset.card_le_card_of_injOn _ hmaps hinj
  have h0 : (0 : Nat) ∈ Finset.range (n + 1) := Finset.mem_range.2 (by omega)
  have hrm : r ∈ (Finset.range (n + 1)).erase 0 :=
    Finset.mem_erase.2 ⟨by omega, Finset.mem_range.2 (by omega)⟩
  rw [Finset.card_erase_of_mem hrm, Finset.card_erase_of_mem h0, Finset.card_range,
    Finset.card_range] at hcard
  omega

/-- Rotating the description of one route keeps the invariant. -/
theorem Rep_isRotated {I : Instance} {s : Solution} {A : Nat → List Int} (hR : Rep I s A)
    {r : Nat} {l : List Int} (hr : A r ~r l) : Rep I s (upd A r l) := by
  have hne : l ≠ [] ↔ A r ≠ [] := by
    constructor
    · intro h2 h3; rw [h3] at hr; exact h2 (List.isRotated_nil_iff'.1 hr).symm
    · intro h2 h3; subst h3; exact h2 (List.isRotated_nil_iff.1 hr)
  have key : ∀ r2, upd A r l r2 ≠ [] → A r2 ≠ [] := by
    intro r2 h
    by_cases e : r2 = r
    · subst e; rw [upd_same] at h; exact hne.1 h
    · rwa [upd_other _ _ _ _ e] at h
  exact
    { routes := fun r2 => by
        by_cases e : r2 = r
        · subst e; rw [upd_same]; exact RouteRep_isRotated hr (hR.routes r2)
        · rw [upd_other _ _ _ _ e]; exact hR.routes r2
      bound := fun r2 h => hR.bound r2 (key r2 h)
      unserved := hR.unserved
      pool_le := hR.pool_le
      pool_absent := fun i h1 h2 => by
        obtain ⟨a, b, c⟩ := hR.pool_absent i h1 h2
        refine ⟨?_, b, c⟩
        by_cases e : s.routes_pool.array i = r
        · rw [e, upd_same]
          rw [e] at a
          by_contra hl
          exact hne.1 hl a
        · rw [upd_other _ _ _ _ e]; exact a
      pool_inj := hR.pool_inj
      pool_nonneg := hR.pool_nonneg
      pool_cap := hR.pool_cap }

/-- Update rule: an operation that only touches route `r`, customers of `r` and customers
that were unserved, and keeps `r` in the solution, preserves the invariant once the new
description of `r` is established. -/
theorem Rep_update {I : Instance} {s s2 : Solution} {A : Nat → List Int} {r : Nat}
    {l2 : List Int} (hR : Rep I s A) (hAr : A r ≠ []) (hl : l2 ≠ [])
    (hpool : s2.routes_pool = s.routes_pool)
    (hmax : s2.max_number_routes = s.max_number_routes)
    (hroutes : ∀ r2, r2 ≠ r → RouteNode.agree (s2.routes_list r2) (s.routes_list r2))
    (hcusts : ∀ u, u ≠ 0 → u ∉ A r → u ∉ l2 →
      CustomerNode.agree (s2.customers_list u) (s.customers_list u))
    (hnew : ∀ u ∈ l2, u ≠ 0 → u ∉ A r → (s.customers_list u).route_ptr = 0)
    (hold : ∀ u ∈ A r, u ≠ 0 → u ∉ l2 → (s2.customers_list u).route_ptr = 0 ∧
      (s2.customers_list u).next = -1 ∧ (s2.customers_list u).prev = -1)
    (hrr : RouteRep I s2 r l2) : Rep I s2 (upd A r l2) := by
  have hr0 : r ≠ 0 := by
    have := (hR.bound r hAr).1
    omega
  have hout : ∀ r2, r2 ≠ r → ∀ u ∈ A r2, u ≠ 0 → u ∉ A r ∧ u ∉ l2 := by
    intro r2 e u hu h0
    have h1 : u ∉ A r := hR.not_mem_of_ne (Ne.symm e) h0 hu
    refine ⟨h1, fun h2 => ?_⟩
    have := hnew u h2 h0 h1
    have b := ((hR.routes r2).mem_iff u h0).1 hu
    rw [this] at b
    exact b.2 b.1.symm
  exact
    { routes := fun r2 => by
        by_cases e : r2 = r
        · subst e; rw [upd_same]; exact hrr
        · rw [upd_other _ _ _ _ e]
          refine RouteRep_frame (hR.routes r2) (hroutes r2 e) ?_ ?_
          · intro u hu h0
            exact hcusts u h0 (hout r2 e u hu h0).1 (hout r2 e u hu h0).2
          · intro u h0 hu hp
            by_contra hr2
            by_cases m2 : u ∈ l2
            · have := ((hrr.mem_iff u h0).1 m2).1
              exact e (hp.symm.trans this)
            · by_cases m1 : u ∈ A r
              · have := (hold u m1 h0 m2).1
                exact hr2 (hp.symm.trans this)
              · have := (hcusts u h0 m1 m2).2.2.1
                rw [this] at hp
                exact hu (((hR.routes r2).mem_iff u h0).2 ⟨hp, hr2⟩)
      bound := fun r2 h => by
        rw [hmax]
        by_cases e : r2 = r
        · subst e; exact hR.bound r2 hAr
        · rw [upd_other _ _ _ _ e] at h; exact hR.bound r2 h
      unserved := fun v h1 h2 h3 => by
        have h0 : v ≠ 0 := by omega
        by_cases m2 : v ∈ l2
        · have := ((hrr.mem_iff v h0).1 m2).1
          rw [h3] at this
          exact absurd this.symm hr0
        · by_cases m1 : v ∈ A r
          · exact (hold v m1 h0 m2).2
          · obtain ⟨c1, c2, c3, _⟩ := hcusts v h0 m1 m2
            rw [c1, c2]
            rw [c3] at h3
            exact hR.unserved v h1 h2 h3
      pool_le := by rw [hpool]; exact hR.pool_le
      pool_absent := fun i h1 h2 => by
        rw [hpool] at h1 h2 ⊢
        rw [hmax]
        obtain ⟨a, b, c⟩ := hR.pool_absent i h1 h2
        refine ⟨?_, b, c⟩
        by_cases e : s.routes_pool.array i = r
        · rw [e] at a; exact absurd a hAr
        · rw [upd_other _ _ _ _ e]; exact a
      pool_inj := by rw [hpool]; exact hR.pool_inj
      pool_nonneg := by rw [hpool]; exact hR.pool_nonneg
      pool_cap := by rw [hpool, hmax]; exact hR.pool_cap }

/-! ## The cost invariant under the update of one route -/

theorem sum_upd (f : Nat → List Int) (g : List Int → Int) (n r : Nat) (l : List Int)
    (hr : r < n) :
    ∑ i in Finset.range n, g (upd f r l i) = ∑ i in Finset.range n, g (f i) + (g l - g (f r)) := by
  have hmem : r ∈ Finset.range n := Finset.mem_range.2 hr
  rw [← Finset.add_sum_erase _ _ hmem, ← Finset.add_sum_erase (Finset.range n) (fun i => g (f i)) hmem]
  have : ∑ i in (Finset.range n).erase r, g (upd f r l i) =
      ∑ i in (Finset.range n).erase r, g (f i) := by
    apply Finset.sum_congr rfl
    intro i hi
    rw [upd_other _ _ _ _ (Finset.ne_of_mem_erase hi)]
  rw [this, upd_same]
  ring

theorem CostOK_update {I : Instance} {s s2 : Solution} {A : Nat → List Int} {r : Nat}
    {l2 : List Int} (hC : CostOK I s A) (hr : r < s.max_number_routes)
    (hmax : s2.max_number_routes = s.max_number_routes)
    (hcost : s2.solution_cost = s.solution_cost + (cycCost I.cost l2 - cycCost I.cost (A r))) :
    CostOK I s2 (upd A r l2) := by
  unfold CostOK at hC ⊢
  rw [hmax, sum_upd A (cycCost I.cost) _ r l2 hr, hcost, hC]

theorem CostOK_isRotated {I : Instance} {s : Solution} {A : Nat → List Int} {r : Nat}
    {l : List Int} (hC : CostOK I s A) (hr : A r ~r l) : CostOK I s (upd A r l) := by
  unfold CostOK at hC ⊢
  rw [hC]
  apply Finset.sum_congr rfl
  intro i _
  by_cases e : i = r
  · subst e; rw [upd_same]; exact (cycCost_isRotated hr).symm
  · rw [upd_other _ _ _ _ e]

/-! ## Effect of `remove_vertex` -/

namespace Solution

theorem get_next_vertex_zero (s : Solution) (r : Nat) :
    s.get_next_vertex r 0 = (s.routes_list r).first_customer := by simp [get_next_vertex]

theorem get_prev_vertex_zero (s : Solution) (r : Nat) :
    s.get_prev_vertex r 0 = (s.routes_list r).last_customer := by simp [get_prev_vertex]

theorem get_cost_prev_vertex_zero (s : Solution) (r : Nat) :
    s.get_cost_prev_vertex r 0 = (s.routes_list r).c_prev_curr := by simp [get_cost_prev_vertex]

theorem get_next_vertex_ne (s : Solution) (r : Nat) {u : Int} (h : u ≠ 0) :
    s.get_next_vertex r u = (s.customers_list u).next := by simp [get_next_vertex, h]

theorem get_prev_vertex_ne (s : Solution) (r : Nat) {u : Int} (h : u ≠ 0) :
    s.get_prev_vertex r u = (s.customers_list u).prev := by simp [get_prev_vertex, h]

theorem get_cost_prev_vertex_ne (s : Solution) (r : Nat) {u : Int} (h : u ≠ 0) :
    s.get_cost_prev_vertex r u = (s.customers_list u).c_prev_curr := by
  simp [get_cost_prev_vertex, h]

section Remove

variable (I : Instance) (s : Solution) (ra : Bool) (r : Nat) (v : Int)

theorem remove_vertex_next (hpre : RemovePre s r v) (u : Int) (hu : u ≠ v) :
    (remove_vertex I s ra r v).1.get_next_vertex r u =
      if u = s.get_prev_vertex r v then s.get_next_vertex r v else s.get_next_vertex r u := by
  by_cases hv : v = 0
  · obtain ⟨h1, h2⟩ := hpre.2 hv
    subst hv
    simp only [remove_vertex, if_true]
    simp [get_next_vertex, get_prev_vertex, hu, h1, h2]
  · obtain ⟨hfirst, hlast⟩ := hpre.1 hv
    simp only [remove_vertex, hv, if_false]
    by_cases h1 : v = (s.routes_list r).first_customer
    · have hp := hfirst.1 h1
      simp [get_next_vertex, get_prev_vertex, reset_vertex, hu, hv, ← h1, hp]
      split_ifs <;> first | rfl | omega | simp_all
    · have hp := mt hfirst.2 h1
      by_cases h2 : v = (s.routes_list r).last_customer
      · have hn := hlast.1 h2
        simp [get_next_vertex, get_prev_vertex, reset_vertex, hu, hv, h1, ← h2, hp, hn]
        split_ifs <;> first | rfl | omega | simp_all
      · have hn := mt hlast.2 h2
        simp [get_next_vertex, get_prev_vertex, reset_vertex, hu, hv, h1, h2, hp, hn]
        split_ifs <;> first | rfl | omega | simp_all

theorem remove_vertex_prev (hpre : RemovePre s r v) (u : Int) (hu : u ≠ v) :
    (remove_vertex I s ra r v).1.get_prev_vertex r u =
      if u = s.get_next_vertex r v then s.get_prev_vertex r v else s.get_prev_vertex r u := by
  by_cases hv : v = 0
  · obtain ⟨h1, h2⟩ := hpre.2 hv
    subst hv
    simp only [remove_vertex, if_true]
    simp [get_next_vertex, get_prev_vertex, hu, h1, h2]
  · obtain ⟨hfirst, hlast⟩ := hpre.1 hv
    simp only [remove_vertex, hv, if_false]
    by_cases h1 : v = (s.routes_list r).first_customer
    · have hp := hfirst.1 h1
      simp [get_next_vertex, get_prev_vertex, reset_vertex, hu, hv, ← h1, hp]
      split_ifs <;> first | rfl | omega | simp_all
    · have hp := mt hfirst.2 h1
      by_cases h2 : v = (s.routes_list r).last_customer
      · have hn := hlast.1 h2
        simp [get_next_vertex, get_prev_vertex, reset_vertex, hu, hv, h1, ← h2, hp, hn]
        split_ifs <;> first | rfl | omega | simp_all
      · have hn := mt hlast.2 h2
        simp [get_next_vertex, get_prev_vertex, reset_vertex, hu, hv, h1, h2, hp, hn]
        split_ifs <;> first | rfl | omega | simp_all

theorem remove_vertex_cc (hpre : RemovePre s r v) (u : Int) (hu : u ≠ v) :
    (remove_vertex I s ra r v).1.get_cost_prev_vertex r u =
      if u = s.get_next_vertex r v then I.cost (s.get_prev_vertex r v) (s.get_next_vertex r v)
      else s.get_cost_prev_vertex r u := by
  by_cases hv : v = 0
  · obtain ⟨h1, h2⟩ := hpre.2 hv
    subst hv
    simp only [remove_vertex, if_true]
    simp [get_next_vertex, get_prev_vertex, get_cost_prev_vertex, hu, h1, h2]
  · simp only [remove_vertex, hv, if_false]
    simp [get_next_vertex, get_prev_vertex, get_cost_prev_vertex, reset_vertex, hu, hv]
    split_ifs <;> first | rfl | omega | simp_all

theorem remove_vertex_self :
    (remove_vertex I s ra r v).1.get_next_vertex r v = -1 ∧
    (remove_vertex I s ra r v).1.get_prev_vertex r v = -1 := by
  by_cases hv : v = 0
  · subst hv
    simp only [remove_vertex, if_true]
    simp [get_next_vertex, get_prev_vertex]
  · simp only [remove_vertex, hv, if_false]
    simp [get_next_vertex, get_prev_vertex, reset_vertex, hv]

theorem remove_vertex_customers_list (u : Int) (hu : u ≠ v)
    (h1 : u ≠ s.get_prev_vertex r v) (h2 : u ≠ s.get_next_vertex r v) :
    CustomerNode.agree ((remove_vertex I s ra r v).1.customers_list u) (s.customers_list u) := by
  unfold CustomerNode.agree
  by_cases hv : v = 0
  · subst hv
    simp only [remove_vertex, if_true]
    simp only [get_prev_vertex, get_next_vertex, if_true] at h1 h2
    simp [hu, h1, h2]
  · simp only [remove_vertex, hv, if_false]
    simp only [get_prev_vertex, get_next_vertex, hv, if_false] at h1 h2
    simp [reset_vertex, hu, h1, h2]

theorem remove_vertex_routes_list (r2 : Nat) (hr : r2 ≠ r) :
    RouteNode.agree ((remove_vertex I s ra r v).1.routes_list r2) (s.routes_list r2) := by
  unfold RouteNode.agree
  by_cases hv : v = 0
  · subst hv
    simp only [remove_vertex, if_true]
    simp [hr]
  · simp only [remove_vertex, hv, if_false]
    simp [reset_vertex, hr]

theorem remove_vertex_route_ptr (u : Int) :
    ((remove_vertex I s ra r v).1.customers_list u).route_ptr =
      if u = v ∧ v ≠ 0 then 0 else (s.customers_list u).route_ptr := by
  by_cases hv : v = 0
  · subst hv
    simp only [remove_vertex, if_true]
    simp
  · simp only [remove_vertex, hv, if_false]
    simp [reset_vertex, hv]

theorem remove_vertex_load :
    ((remove_vertex I s ra r v).1.routes_list r).load =
      (s.routes_list r).load - (if v = 0 then 0 else I.demand v) := by
  by_cases hv : v = 0
  · subst hv
    simp only [remove_vertex, if_true]
    simp
  · simp only [remove_vertex, hv, if_false]
    simp [reset_vertex, hv]

theorem remove_vertex_size :
    ((remove_vertex I s ra r v).1.routes_list r).size =
      (s.routes_list r).size - (if v = 0 then 0 else 1) := by
  by_cases hv : v = 0
  · subst hv
    simp only [remove_vertex, if_true]
    simp
  · simp only [remove_vertex, hv, if_false]
    simp [reset_vertex, hv]

theorem remove_vertex_in_solution (r2 : Nat) :
    ((remove_vertex I s ra r v).1.routes_list r2).in_solution = (s.routes_list r2).in_solution := by
  by_cases hv : v = 0
  · subst hv
    simp only [remove_vertex, if_true]
    simp
  · simp only [remove_vertex, hv, if_false]
    simp [reset_vertex, hv]

theorem remove_vertex_cost :
    (remove_vertex I s ra r v).1.solution_cost =
      s.solution_cost + (I.cost (s.get_prev_vertex r v) (s.get_next_vertex r v)
        - I.cost (s.get_prev_vertex r v) v - I.cost v (s.get_next_vertex r v)) := by
  by_cases hv : v = 0
  · subst hv
    simp only [remove_vertex, if_true]
    simp [get_next_vertex, get_prev_vertex]
  · simp only [remove_vertex, hv, if_false]
    simp [get_next_vertex, get_prev_vertex, reset_vertex, hv]

theorem remove_vertex_delta :
    (remove_vertex I s ra r v).2 = I.cost (s.get_prev_vertex r v) (s.get_next_vertex r v)
        - I.cost (s.get_prev_vertex r v) v - I.cost v (s.get_next_vertex r v) := by
  by_cases hv : v = 0
  · subst hv
    simp only [remove_vertex, if_true]
    simp [get_next_vertex, get_prev_vertex]
  · simp only [remove_vertex, hv, if_false]
    simp [get_next_vertex, get_prev_vertex, reset_vertex, hv]

theorem remove_vertex_pool :
    (remove_vertex I s ra r v).1.routes_pool = s.routes_pool ∧
    (remove_vertex I s ra r v).1.max_number_routes = s.max_number_routes ∧
    (remove_vertex I s ra r v).1.depot_node = s.depot_node := by
  by_cases hv : v = 0
  · subst hv
    simp only [remove_vertex, if_true]
    simp
  · simp only [remove_vertex, hv, if_false]
    simp [reset_vertex, hv]

theorem remove_vertex_lists :
    (remove_vertex I s ra r v).1.do_list1 =
      (if ra then s.do_list1 ++ [Action.remove_vertex r v] else s.do_list1) ∧
    (remove_vertex I s ra r v).1.undo_list1 =
      (if ra then s.undo_list1 ++ [Action.insert_vertex r (s.get_next_vertex r v) v]
       else s.undo_list1) := by
  by_cases hv : v = 0
  · subst hv
    simp only [remove_vertex, if_true]
    simp
  · simp only [remove_vertex, hv, if_false]
    simp [reset_vertex, hv]

end Remove

end Solution

theorem cycCost_eq {cost : Int → Int → Int} (x : Int) (t : List Int) :
    cycCost cost (x :: t) = segCost cost x t + cost (lastFrom x t) x := by
  rw [cycCost_cons, segCost_append]
  simp

section RemoveRep

variable {I : Instance} {s : Solution} {A : Nat → List Int} {r : Nat} {v : Int} {t : List Int}

/-- In a represented solution the position tests of `remove_vertex` mean what they should. -/
theorem removePre_of_rep (hR : Rep I s A) (hA : A r = v :: t) (ht : t ≠ []) :
    s.RemovePre r v := by
  have rr := hR.routes r
  rw [hA] at rr
  obtain ⟨n, t2, rfl⟩ := List.exists_cons_of_ne_nil ht
  have hcyc := rr.cycle (by simp)
  obtain ⟨c1, c2, _, _, c5, c6, _⟩ := IsCycle_head hcyc
  have hf := IsCycle_facts hcyc
  have hnd := rr.nodup
  have hvt : v ∉ n :: t2 := (List.nodup_cons.1 hnd).1
  have hp : lastFrom n t2 ∈ n :: t2 := lastFrom_mem n t2
  constructor
  · intro hv
    rw [Solution.get_next_vertex_ne _ _ hv] at c1
    rw [Solution.get_prev_vertex_ne _ _ hv] at c6
    constructor
    · constructor
      · intro h1
        by_cases h0 : (0 : Int) ∈ v :: n :: t2
        · have := (hf 0 h0).1
          rw [Solution.get_next_vertex_zero, ← h1, Solution.get_prev_vertex_ne _ _ hv] at this
          exact this
        · have := (rr.missing (by simp) h0).1
          have hr := (rr.range v (by simp)).1
          omega
      · intro h1
        rw [c6] at h1
        rw [h1, Solution.get_next_vertex_zero] at c5
        exact c5.symm
    · constructor
      · intro h1
        by_cases h0 : (0 : Int) ∈ v :: n :: t2
        · have := (hf 0 h0).2.1
          rw [Solution.get_prev_vertex_zero, ← h1, Solution.get_next_vertex_ne _ _ hv] at this
          exact this
        · have := (rr.missing (by simp) h0).2
          have hr := (rr.range v (by simp)).1
          omega
      · intro h1
        rw [c1] at h1
        rw [h1, Solution.get_prev_vertex_zero] at c2
        exact c2.symm
  · intro hv
    subst hv
    rw [Solution.get_next_vertex_zero] at c1
    rw [Solution.get_prev_vertex_zero] at c6
    rw [c1, c6]
    constructor
    · rintro rfl; exact hvt (by simp)
    · intro h; rw [h] at hp; exact hvt hp

theorem remove_vertex_routeRep (ra : Bool) (hR : Rep I s A) (hA : A r = v :: t) (ht : t ≠ []) :
    RouteRep I (Solution.remove_vertex I s ra r v).1 r t := by
  have hpre := removePre_of_rep hR hA ht
  have rr := hR.routes r
  rw [hA] at rr
  obtain ⟨n, t2, rfl⟩ := List.exists_cons_of_ne_nil ht
  obtain ⟨c1, c2, c3, c4, c5, c6, c7⟩ := IsCycle_head (rr.cycle (by simp))
  have hnd := rr.nodup
  have hvt : v ∉ n :: t2 := (List.nodup_cons.1 hnd).1
  have hnd2 : (n :: t2).Nodup := (List.nodup_cons.1 hnd).2
  have hp : lastFrom n t2 ∈ n :: t2 := lastFrom_mem n t2
  have hne : ∀ u ∈ n :: t2, u ≠ v := fun u hu e => hvt (e ▸ hu)
  have enx : ∀ u ∈ n :: t2, (Solution.remove_vertex I s ra r v).1.get_next_vertex r u =
      if u = lastFrom n t2 then n else s.get_next_vertex r u := by
    intro u hu
    have := Solution.remove_vertex_next I s ra r v hpre u (hne u hu)
    rw [c6, c1] at this; exact this
  have epv : ∀ u ∈ n :: t2, (Solution.remove_vertex I s ra r v).1.get_prev_vertex r u =
      if u = n then lastFrom n t2 else s.get_prev_vertex r u := by
    intro u hu
    have := Solution.remove_vertex_prev I s ra r v hpre u (hne u hu)
    rw [c6, c1] at this; exact this
  have ecc : ∀ u ∈ n :: t2, (Solution.remove_vertex I s ra r v).1.get_cost_prev_vertex r u =
      if u = n then I.cost (lastFrom n t2) n else s.get_cost_prev_vertex r u := by
    intro u hu
    have := Solution.remove_vertex_cc I s ra r v hpre u (hne u hu)
    rw [c6, c1] at this; exact this
  exact
    { present_iff := by
        rw [Solution.remove_vertex_in_solution, ← rr.present_iff]; simp
      cycle := fun _ => by
        rw [IsCycle_cons, Seg_append]
        refine ⟨Seg_frame n t2 ?_ ?_ c4, ?_⟩
        · intro u hu
          rw [enx u (initFrom_subset n t2 u hu), if_neg]
          rintro rfl; exact lastFrom_not_mem_initFrom n t2 hnd2 hu
        · intro u hu
          have hun : u ≠ n := by rintro rfl; exact (List.nodup_cons.1 hnd2).1 hu
          rw [epv u (List.mem_cons_of_mem _ hu), ecc u (List.mem_cons_of_mem _ hu),
            if_neg hun, if_neg hun]
          exact ⟨rfl, rfl⟩
        · simp only [Seg_cons, Seg_nil, and_true]
          rw [enx _ hp, epv n (by simp), ecc n (by simp)]
          simp
      nodup := hnd2
      range := fun u hu => rr.range u (List.mem_cons_of_mem _ hu)
      mem_iff := fun u h0 => by
        rw [Solution.remove_vertex_route_ptr]
        by_cases e : u = v
        · subst e
          simp only [true_and, h0, ne_eq, not_false_eq_true, if_true]
          constructor
          · intro h; exact absurd h hvt
          · rintro ⟨h1, h2⟩; exact absurd h1.symm h2
        · have := rr.mem_iff u h0
          simp only [List.mem_cons, e, false_or] at this
          simp only [e, false_and, if_false]
          simpa using this
      load := fun _ => by
        rw [Solution.remove_vertex_load, rr.load (by simp), loadOf_cons I v]
        ring
      size := fun _ => by
        rw [Solution.remove_vertex_size, rr.size (by simp), sizeOf_cons v]
        ring
      missing := fun _ h0 => by
        by_cases hv : v = 0
        · subst hv
          have := Solution.remove_vertex_self I s ra r 0
          rwa [Solution.get_next_vertex_zero, Solution.get_prev_vertex_zero] at this
        · have hm := rr.missing (by simp) (by
            simp only [List.mem_cons, not_or] at h0 ⊢
            exact ⟨fun h => hv h.symm, h0.1, h0.2⟩)
          have a := Solution.remove_vertex_next I s ra r v hpre 0 (Ne.symm hv)
          have b := Solution.remove_vertex_prev I s ra r v hpre 0 (Ne.symm hv)
          rw [c6, c1, Solution.get_next_vertex_zero, Solution.get_next_vertex_zero] at a
          rw [c6, c1, Solution.get_prev_vertex_zero, Solution.get_prev_vertex_zero] at b
          have hp0 : (0 : Int) ≠ lastFrom n t2 := fun e => h0 (e ▸ hp)
          have hn0 : (0 : Int) ≠ n := fun e => h0 (e ▸ List.mem_cons_self _ _)
          rw [if_neg hp0] at a
          rw [if_neg hn0] at b
          rw [a, b]; exact hm }

/-- Removing the head `v` of the cycle `v :: t` of route `r` leaves the cycle `t`. -/
theorem remove_vertex_rep (ra : Bool) (hR : Rep I s A) (hA : A r = v :: t) (ht : t ≠ []) :
    Rep I (Solution.remove_vertex I s ra r v).1 (upd A r t) := by
  have hrr := remove_vertex_routeRep ra hR hA ht
  have rr := hR.routes r
  rw [hA] at rr
  have hAr : A r ≠ [] := by rw [hA]; simp
  obtain ⟨n, t2, rfl⟩ := List.exists_cons_of_ne_nil ht
  obtain ⟨c1, _, _, _, _, c6, _⟩ := IsCycle_head (rr.cycle (by simp))
  have hp : lastFrom n t2 ∈ n :: t2 := lastFrom_mem n t2
  obtain ⟨p1, p2, _⟩ := Solution.remove_vertex_pool I s ra r v
  refine Rep_update hR hAr (by simp) p1 p2 (Solution.remove_vertex_routes_list I s ra r v) ?_ ?_ ?_ hrr
  · intro u _ h1 _
    rw [hA] at h1
    refine Solution.remove_vertex_customers_list I s ra r v u ?_ ?_ ?_
    · rintro rfl; exact h1 (by simp)
    · rw [c6]; rintro rfl; exact h1 (List.mem_cons_of_mem _ hp)
    · rw [c1]; rintro rfl; exact h1 (by simp)
  · intro u hu _ h1
    rw [hA] at h1
    exact absurd (List.mem_cons_of_mem _ hu) h1
  · intro u hu h0 h1
    rw [hA] at hu
    have e : u = v := by
      rcases List.mem_cons.1 hu with e | e
      · exact e
      · exact absurd e h1
    subst e
    have := Solution.remove_vertex_self I s ra r u
    rw [Solution.get_next_vertex_ne _ _ h0, Solution.get_prev_vertex_ne _ _ h0] at this
    refine ⟨?_, this.1, this.2⟩
    rw [Solution.remove_vertex_route_ptr]
    simp [h0]

theorem remove_vertex_cost_eq (ra : Bool) (hR : Rep I s A) (hA : A r = v :: t) (ht : t ≠ []) :
    (Solution.remove_vertex I s ra r v).1.solution_cost =
      s.solution_cost + (cycCost I.cost t - cycCost I.cost (A r)) := by
  have rr := hR.routes r
  rw [hA] at rr ⊢
  obtain ⟨n, t2, rfl⟩ := List.exists_cons_of_ne_nil ht
  obtain ⟨c1, _, _, _, _, c6, _⟩ := IsCycle_head (rr.cycle (by simp))
  rw [Solution.remove_vertex_cost, c1, c6, cycCost_head, cycCost_eq]
  ring

theorem remove_vertex_costOK (ra : Bool) (hR : Rep I s A) (hC : CostOK I s A)
    (hA : A r = v :: t) (ht : t ≠ []) :
    CostOK I (Solution.remove_vertex I s ra r v).1 (upd A r t) := by
  have hAr : A r ≠ [] := by rw [hA]; simp
  exact CostOK_update hC (hR.bound r hAr).2 (Solution.remove_vertex_pool I s ra r v).2.1
    (remove_vertex_cost_eq ra hR hA ht)

end RemoveRep

/-! ## Effect of `insert_vertex_before` -/

namespace Solution

section Insert

variable (I : Instance) (s : Solution) (ra : Bool) (r : Nat) (w v : Int)

theorem insert_vertex_next (hpre : s.InsertPre r w v) (u : Int) :
    (insert_vertex_before I s ra r w v).get_next_vertex r u =
      if u = v then w else if u = s.get_prev_vertex r w then v else s.get_next_vertex r u := by
  obtain ⟨h1, h2, h3⟩ := hpre
  by_cases hv : v = 0
  · obtain ⟨h4, h5⟩ := h3 hv
    subst hv
    simp only [get_prev_vertex, h4, if_false] at h5 ⊢
    simp only [insert_vertex_before, if_true]
    simp [get_next_vertex, h4, h5]
    split_ifs <;> first | rfl | omega | simp_all
  · simp only [insert_vertex_before, hv, if_false]
    by_cases hw : w = 0
    · subst hw
      simp only [get_prev_vertex, if_true] at h2 ⊢
      simp [get_next_vertex, hv]
      split_ifs <;> first | rfl | omega | (exfalso; omega) | simp_all
    · simp only [get_prev_vertex, hw, if_false] at h2 ⊢
      simp [get_next_vertex, hv]
      split_ifs <;> first | rfl | omega | (exfalso; omega) | simp_all

theorem insert_vertex_prev (hpre : s.InsertPre r w v) (u : Int) :
    (insert_vertex_before I s ra r w v).get_prev_vertex r u =
      if u = w then v else if u = v then s.get_prev_vertex r w else s.get_prev_vertex r u := by
  obtain ⟨h1, h2, h3⟩ := hpre
  by_cases hv : v = 0
  · obtain ⟨h4, h5⟩ := h3 hv
    subst hv
    simp only [get_prev_vertex, h4, if_false] at h5 ⊢
    simp only [insert_vertex_before, if_true]
    simp [get_prev_vertex, h4, h5]
    split_ifs <;> first | rfl | omega | simp_all
  · simp only [insert_vertex_before, hv, if_false]
    by_cases hw : w = 0
    · subst hw
      simp only [get_prev_vertex, if_true] at h2 ⊢
      simp [hv]
      split_ifs <;> first | rfl | omega | (exfalso; omega) | simp_all
    · simp only [get_prev_vertex, hw, if_false] at h2 ⊢
      simp [hv, hw]
      split_ifs <;> first | rfl | omega | (exfalso; omega) | simp_all

theorem insert_vertex_cc (hpre : s.InsertPre r w v) (u : Int) :
    (insert_vertex_before I s ra r w v).get_cost_prev_vertex r u =
      if u = v then I.cost (s.get_prev_vertex r w) v
      else if u = w then I.cost v w else s.get_cost_prev_vertex r u := by
  obtain ⟨h1, h2, h3⟩ := hpre
  by_cases hv : v = 0
  · obtain ⟨h4, h5⟩ := h3 hv
    subst hv
    simp only [get_prev_vertex, h4, if_false] at h5 ⊢
    simp only [insert_vertex_before, if_true]
    simp [get_cost_prev_vertex, h4, h5]
    split_ifs <;> first | rfl | omega | simp_all
  · simp only [insert_vertex_before, hv, if_false]
    by_cases hw : w = 0
    · subst hw
      simp only [get_prev_vertex, if_true] at h2 ⊢
      simp [get_cost_prev_vertex, hv]
      split_ifs <;> first | rfl | omega | (exfalso; omega) | simp_all
    · simp only [get_prev_vertex, hw, if_false] at h2 ⊢
      simp [get_cost_prev_vertex, hv, hw]
      split_ifs <;> first | rfl | omega | (exfalso; omega) | simp_all

theorem insert_vertex_customers_list (hpre : s.InsertPre r w v) (u : Int) (hu : u ≠ v)
    (h1 : u ≠ s.get_prev_vertex r w) (h2 : u ≠ w) :
    CustomerNode.agree ((insert_vertex_before I s ra r w v).customers_list u)
      (s.customers_list u) := by
  unfold CustomerNode.agree
  obtain ⟨_, _, h3⟩ := hpre
  by_cases hv : v = 0
  · obtain ⟨h4, h5⟩ := h3 hv
    subst hv
    simp only [get_prev_vertex, h4, if_false] at h1
    simp only [insert_vertex_before, if_true]
    simp [hu, h1, h2]
  · simp only [insert_vertex_before, hv, if_false]
    by_cases hw : w = 0
    · subst hw
      simp only [get_prev_vertex, if_true] at h1
      simp [get_prev_vertex, hu, h1, h2]
    · simp only [get_prev_vertex, hw, if_false] at h1
      simp [get_prev_vertex, hw, hu, h1, h2]

theorem insert_vertex_routes_list (r2 : Nat) (hr : r2 ≠ r) :
    RouteNode.agree ((insert_vertex_before I s ra r w v).routes_list r2) (s.routes_list r2) := by
  unfold RouteNode.agree
  by_cases hv : v = 0
  · subst hv
    simp only [insert_vertex_before, if_true]
    simp [hr]
  · simp only [insert_vertex_before, hv, if_false]
    simp [hr]

theorem insert_vertex_route_ptr (u : Int) :
    ((insert_vertex_before I s ra r w v).customers_list u).route_ptr =
      if u = v ∧ v ≠ 0 then r else (s.customers_list u).route_ptr := by
  by_cases hv : v = 0
  · subst hv
    simp only [insert_vertex_before, if_true]
    simp
  · simp only [insert_vertex_before, hv, if_false]
    simp [hv]

theorem insert_vertex_load :
    ((insert_vertex_before I s ra r w v).routes_list r).load =
      (s.routes_list r).load + (if v = 0 then 0 else I.demand v) := by
  by_cases hv : v = 0
  · subst hv
    simp only [insert_vertex_before, if_true]
    simp
  · simp only [insert_vertex_before, hv, if_false]
    simp [hv]

theorem insert_vertex_size :
    ((insert_vertex_before I s ra r w v).routes_list r).size =
      (s.routes_list r).size + (if v = 0 then 0 else 1) := by
  by_cases hv : v = 0
  · subst hv
    simp only [insert_vertex_before, if_true]
    simp
  · simp only [insert_vertex_before, hv, if_false]
    simp [hv]

theorem insert_vertex_in_solution (r2 : Nat) :
    ((insert_vertex_before I s ra r w v).routes_list r2).in_solution =
      (s.routes_list r2).in_solution := by
  by_cases hv : v = 0
  · subst hv
    simp only [insert_vertex_before, if_true]
    simp
  · simp only [insert_vertex_before, hv, if_false]
    simp [hv]

theorem insert_vertex_cost (hpre : s.InsertPre r w v) :
    (insert_vertex_before I s ra r w v).solution_cost =
      s.solution_cost + (I.cost (s.get_prev_vertex r w) v + I.cost v w
        - s.get_cost_prev_vertex r w) := by
  obtain ⟨h1, h2, h3⟩ := hpre
  by_cases hv : v = 0
  · obtain ⟨h4, h5⟩ := h3 hv
    subst hv
    simp only [get_prev_vertex, h4, if_false] at h5 ⊢
    simp only [insert_vertex_before, if_true]
    simp [get_cost_prev_vertex, h4, h5]
  · simp only [insert_vertex_before, hv, if_false]
    simp [get_cost_prev_vertex, get_prev_vertex, hv, h1]

theorem insert_vertex_pool :
    (insert_vertex_before I s ra r w v).routes_pool = s.routes_pool ∧
    (insert_vertex_before I s ra r w v).max_number_routes = s.max_number_routes ∧
    (insert_vertex_before I s ra r w v).depot_node = s.depot_node := by
  by_cases hv : v = 0
  · subst hv
    simp only [insert_vertex_before, if_true]
    simp
  · simp only [insert_vertex_before, hv, if_false]
    simp [hv]

theorem insert_vertex_lists :
    (insert_vertex_before I s ra r w v).do_list1 =
      (if ra then s.do_list1 ++ [Action.insert_vertex r w v] else s.do_list1) ∧
    (insert_vertex_before I s ra r w v).undo_list1 =
      (if ra then s.undo_list1 ++ [Action.remove_vertex r v] else s.undo_list1) := by
  by_cases hv : v = 0
  · subst hv
    simp only [insert_vertex_before, if_true]
    simp
  · simp only [insert_vertex_before, hv, if_false]
    simp [hv]

end Insert

end Solution

section InsertRep

variable {I : Instance} {s : Solution} {A : Nat → List Int} {r : Nat} {w v : Int} {t : List Int}

theorem insertPre_of_rep (hA : A r = w :: t) (hv : v ∉ A r)
    (hc : IsCycle I.cost (s.get_next_vertex r) (s.get_prev_vertex r) (s.get_cost_prev_vertex r)
      (w :: t)) : s.InsertPre r w v := by
  rw [hA] at hv
  have hp := (IsCycle_facts hc w (by simp)).2.2.2.1
  refine ⟨?_, ?_, ?_⟩
  · rintro rfl; exact hv (by simp)
  · intro e; rw [e] at hp; exact hv hp
  · rintro rfl
    constructor
    · rintro rfl; exact hv (by simp)
    · intro e; rw [e] at hp; exact hv hp

theorem IsCycle_last {cost : Int → Int → Int} {nx pv cc : Int → Int} {x : Int} {t : List Int}
    (h : IsCycle cost nx pv cc (x :: t)) :
    Seg cost nx pv cc x t ∧ nx (lastFrom x t) = x ∧ pv x = lastFrom x t ∧
      cc x = cost (lastFrom x t) x := by
  rw [IsCycle_cons, Seg_append] at h
  simpa using h

theorem insert_vertex_routeRep (ra : Bool) (hR : Rep I s A) (hA : A r = w :: t)
    (hv : v ∉ A r) (hv1 : v ≠ 0 → (s.customers_list v).route_ptr = 0)
    (hrange : 0 ≤ v ∧ v < (I.vertices_num : Int)) :
    RouteRep I (Solution.insert_vertex_before I s ra r w v) r (v :: w :: t) := by
  have rr := hR.routes r
  rw [hA] at rr
  have hAr : A r ≠ [] := by rw [hA]; simp
  have hr0 : r ≠ 0 := by have := (hR.bound r hAr).1; omega
  have hcyc := rr.cycle (by simp)
  have hpre := insertPre_of_rep hA hv hcyc
  obtain ⟨c1, c2, c3, c4⟩ := IsCycle_last hcyc
  have hnd := rr.nodup
  rw [hA] at hv
  have hp : lastFrom w t ∈ w :: t := lastFrom_mem w t
  have hne : ∀ u ∈ w :: t, u ≠ v := fun u hu e => hv (e ▸ hu)
  have enx := Solution.insert_vertex_next I s ra r w v hpre
  have epv := Solution.insert_vertex_prev I s ra r w v hpre
  have ecc := Solution.insert_vertex_cc I s ra r w v hpre
  rw [c3] at enx epv ecc
  exact
    { present_iff := by
        rw [Solution.insert_vertex_in_solution, ← rr.present_iff]; simp
      cycle := fun _ => by
        apply IsCycle_of_head
        refine ⟨?_, ?_, ?_, Seg_frame w t ?_ ?_ c1, ?_, ?_, ?_⟩
        · rw [enx]; simp
        · rw [epv]; simp
        · rw [ecc, if_neg (hne w (by simp))]; simp
        · intro u hu
          have hu1 := initFrom_subset w t u hu
          rw [enx, if_neg (hne u hu1), if_neg]
          rintro rfl; exact lastFrom_not_mem_initFrom w t hnd hu
        · intro u hu
          have hu1 : u ∈ w :: t := List.mem_cons_of_mem _ hu
          have huw : u ≠ w := by rintro rfl; exact (List.nodup_cons.1 hnd).1 hu
          rw [epv, ecc, if_neg huw, if_neg (hne u hu1), if_neg (hne u hu1), if_neg huw]
          exact ⟨rfl, rfl⟩
        · rw [enx, if_neg (hne _ hp)]; simp
        · rw [epv, if_neg (Ne.symm (hne w (by simp)))]; simp
        · rw [ecc]; simp
      nodup := List.nodup_cons.2 ⟨hv, hnd⟩
      range := fun u hu => by
        rcases List.mem_cons.1 hu with e | e
        · rw [e]; exact hrange
        · exact rr.range u e
      mem_iff := fun u h0 => by
        rw [Solution.insert_vertex_route_ptr]
        by_cases e : u = v
        · subst e
          simp [h0, hr0]
        · have := rr.mem_iff u h0
          simp only [e, false_and, if_false, List.mem_cons, false_or] at this ⊢
          exact this
      load := fun _ => by
        rw [Solution.insert_vertex_load, rr.load (by simp), loadOf_cons I v]
        ring
      size := fun _ => by
        rw [Solution.insert_vertex_size, rr.size (by simp), sizeOf_cons v]
        ring
      missing := fun _ h0 => by
        have hv0 : (0 : Int) ≠ v := fun e => h0 (e ▸ List.mem_cons_self _ _)
        have h0' : (0 : Int) ∉ w :: t := fun h => h0 (List.mem_cons_of_mem _ h)
        have hm := rr.missing (by simp) h0'
        have a := enx 0
        have b := epv 0
        have hp0 : (0 : Int) ≠ lastFrom w t := fun e => h0' (e ▸ hp)
        have hw0 : (0 : Int) ≠ w := fun e => h0' (e ▸ List.mem_cons_self _ _)
        rw [if_neg hv0, if_neg hp0, Solution.get_next_vertex_zero,
          Solution.get_next_vertex_zero] at a
        rw [if_neg hw0, if_neg hv0, Solution.get_prev_vertex_zero,
          Solution.get_prev_vertex_zero] at b
        rw [a, b]; exact hm }

/-- Inserting `v` before the head `w` of the cycle `w :: t` gives the cycle `v :: w :: t`. -/
theorem insert_vertex_rep (ra : Bool) (hR : Rep I s A) (hA : A r = w :: t)
    (hv : v ∉ A r) (hv1 : v ≠ 0 → (s.customers_list v).route_ptr = 0)
    (hrange : 0 ≤ v ∧ v < (I.vertices_num : Int)) :
    Rep I (Solution.insert_vertex_before I s ra r w v) (upd A r (v :: w :: t)) := by
  have hrr := insert_vertex_routeRep ra hR hA hv hv1 hrange
  have rr := hR.routes r
  rw [hA] at rr
  have hAr : A r ≠ [] := by rw [hA]; simp
  have hcyc := rr.cycle (by simp)
  have hpre := insertPre_of_rep hA hv hcyc
  obtain ⟨_, _, c3, _⟩ := IsCycle_last hcyc
  have hp : lastFrom w t ∈ w :: t := lastFrom_mem w t
  obtain ⟨p1, p2, _⟩ := Solution.insert_vertex_pool I s ra r w v
  refine Rep_update hR hAr (by simp) p1 p2 (Solution.insert_vertex_routes_list I s ra r w v)
    ?_ ?_ ?_ hrr
  · intro u _ h1 h2
    rw [hA] at h1
    refine Solution.insert_vertex_customers_list I s ra r w v hpre u ?_ ?_ ?_
    · rintro rfl; exact h2 (by simp)
    · rw [c3]; rintro rfl; exact h1 hp
    · rintro rfl; exact h1 (by simp)
  · intro u hu h0 h1
    rw [hA] at h1
    rcases List.mem_cons.1 hu with e | e
    · rw [e]; exact hv1 (e ▸ h0)
    · exact absurd e h1
  · intro u hu _ h1
    rw [hA] at hu
    exact absurd (List.mem_cons_of_mem _ hu) h1

theorem insert_vertex_cost_eq (ra : Bool) (hR : Rep I s A) (hA : A r = w :: t) (hv : v ∉ A r) :
    (Solution.insert_vertex_before I s ra r w v).solution_cost =
      s.solution_cost + (cycCost I.cost (v :: w :: t) - cycCost I.cost (A r)) := by
  have rr := hR.routes r
  rw [hA] at rr
  have hcyc := rr.cycle (by simp)
  have hpre := insertPre_of_rep hA hv hcyc
  obtain ⟨_, _, c3, c4⟩ := IsCycle_last hcyc
  rw [Solution.insert_vertex_cost I s ra r w v hpre, c3, c4, hA, cycCost_head, cycCost_eq]
  ring

theorem insert_vertex_costOK (ra : Bool) (hR : Rep I s A) (hC : CostOK I s A)
    (hA : A r = w :: t) (hv : v ∉ A r) :
    CostOK I (Solution.insert_vertex_before I s ra r w v) (upd A r (v :: w :: t)) := by
  have hAr : A r ≠ [] := by rw [hA]; simp
  exact CostOK_update hC (hR.bound r hAr).2 (Solution.insert_vertex_pool I s ra r w v).2.1
    (insert_vertex_cost_eq ra hR hA hv)

end InsertRep

/-! ## Effect of `build_one_customer_route` -/

namespace Solution

section Build

variable (I : Instance) (s : Solution) (ra : Bool) (c : Int)

theorem build_route_eq :
    (build_one_customer_route I s ra c).1 = s.routes_pool.array s.routes_pool.begin := rfl

theorem build_customer :
    ((build_one_customer_route I s ra c).2.customers_list c).next = 0 ∧
    ((build_one_customer_route I s ra c).2.customers_list c).prev = 0 ∧
    ((build_one_customer_route I s ra c).2.customers_list c).route_ptr =
      (build_one_customer_route I s ra c).1 ∧
    ((build_one_customer_route I s ra c).2.customers_list c).c_prev_curr = I.cost 0 c := by
  simp [build_one_customer_route, request_route]

theorem build_customers_list (u : Int) (hu : u ≠ c) :
    CustomerNode.agree ((build_one_customer_route I s ra c).2.customers_list u)
      (s.customers_list u) := by
  unfold CustomerNode.agree
  simp [build_one_customer_route, request_route, hu]

theorem build_route :
    ((build_one_customer_route I s ra c).2.routes_list (build_one_customer_route I s ra c).1
      ).first_customer = c ∧
    ((build_one_customer_route I s ra c).2.routes_list (build_one_customer_route I s ra c).1
      ).last_customer = c ∧
    ((build_one_customer_route I s ra c).2.routes_list (build_one_customer_route I s ra c).1
      ).load = I.demand c ∧
    ((build_one_customer_route I s ra c).2.routes_list (build_one_customer_route I s ra c).1
      ).size = 1 ∧
    ((build_one_customer_route I s ra c).2.routes_list (build_one_customer_route I s ra c).1
      ).in_solution = true ∧
    ((build_one_customer_route I s ra c).2.routes_list (build_one_customer_route I s ra c).1
      ).c_prev_curr = I.cost 0 c := by
  simp [build_one_customer_route, request_route]

theorem build_routes_list (r2 : Nat) (hr : r2 ≠ (build_one_customer_route I s ra c).1) :
    RouteNode.agree ((build_one_customer_route I s ra c).2.routes_list r2) (s.routes_list r2) := by
  unfold RouteNode.agree
  have hr2 : r2 ≠ s.routes_pool.get.1 := hr
  simp [build_one_customer_route, request_route, hr2]

theorem build_scalars :
    (build_one_customer_route I s ra c).2.solution_cost = s.solution_cost + 2 * I.cost 0 c ∧
    (build_one_customer_route I s ra c).2.max_number_routes = s.max_number_routes ∧
    (build_one_customer_route I s ra c).2.routes_pool.begin = s.routes_pool.begin + 1 ∧
    (build_one_customer_route I s ra c).2.routes_pool.capacity = s.routes_pool.capacity ∧
    (build_one_customer_route I s ra c).2.routes_pool.array = s.routes_pool.array ∧
    (build_one_customer_route I s ra c).2.depot_node.num_routes = s.depot_node.num_routes + 1 ∧
    (build_one_customer_route I s ra c).2.cache = s.cache.insert c := by
  simp [build_one_customer_route, request_route, FixedSizeValueStack.get]

theorem build_lists :
    (build_one_customer_route I s ra c).2.do_list1 =
      (if ra then s.do_list1 ++
        [Action.create_one_customer_route (build_one_customer_route I s ra c).1 c]
       else s.do_list1) ∧
    (build_one_customer_route I s ra c).2.undo_list1 =
      (if ra then s.undo_list1 ++
        [Action.remove_one_customer_route (build_one_customer_route I s ra c).1 c]
       else s.undo_list1) := by
  simp [build_one_customer_route, request_route]

end Build

/-! ## Effect of `release_route` and `remove_route` -/

section Release

variable (s : Solution) (ra : Bool) (r : Nat)

theorem remove_route_customers_list :
    (s.remove_route ra r).customers_list = s.customers_list := by
  funext u
  simp [remove_route, release_route, reset_route]

theorem remove_route_routes_list (r2 : Nat) (hr : r2 ≠ r) :
    RouteNode.agree ((s.remove_route ra r).routes_list r2) (s.routes_list r2) := by
  unfold RouteNode.agree
  simp [remove_route, release_route, reset_route, hr]

theorem remove_route_self :
    ((s.remove_route ra r).routes_list r).in_solution = false ∧
    ((s.remove_route ra r).routes_list r).first_customer = -1 ∧
    ((s.remove_route ra r).routes_list r).last_customer = -1 ∧
    ((s.remove_route ra r).routes_list r).load = 0 ∧
    ((s.remove_route ra r).routes_list r).size = 0 := by
  simp [remove_route, release_route, reset_route]

theorem remove_route_scalars :
    (s.remove_route ra r).solution_cost = s.solution_cost ∧
    (s.remove_route ra r).max_number_routes = s.max_number_routes ∧
    (s.remove_route ra r).routes_pool = s.routes_pool.push r ∧
    (s.remove_route ra r).depot_node.num_routes = s.depot_node.num_routes - 1 ∧
    (s.remove_route ra r).cache = s.cache := by
  simp [remove_route, release_route, reset_route]
  split_ifs <;> simp <;> ring

theorem remove_route_lists :
    (s.remove_route ra r).do_list1 =
      (if ra then s.do_list1 ++ [Action.remove_route r] else s.do_list1) ∧
    (s.remove_route ra r).undo_list1 =
      (if ra then s.undo_list1 ++ [Action.create_route r] else s.undo_list1) := by
  simp [remove_route, release_route, reset_route]

end Release

end Solution

section BuildRep

variable {I : Instance} {s : Solution} {A : Nat → List Int}

/-- Building a one-customer route for the unserved customer `c` adds the cycle `[0, c]`
under the index taken from the pool. -/
theorem build_rep (ra : Bool) {c : Int} (hsym : CostSym I) (hR : Rep I s A)
    (hc : 0 < c ∧ c < (I.vertices_num : Int)) (hun : (s.customers_list c).route_ptr = 0)
    (hpool : s.routes_pool.begin < s.routes_pool.capacity) :
    Rep I (Solution.build_one_customer_route I s ra c).2
      (upd A (Solution.build_one_customer_route I s ra c).1 [0, c]) := by
  have hc0 : c ≠ 0 := by omega
  obtain ⟨pa, pb, pc⟩ := hR.pool_absent _ (le_refl _) hpool
  rw [← Solution.build_route_eq I s ra c] at pa pb pc
  obtain ⟨b1, b2, b3, b4⟩ := Solution.build_customer I s ra c
  obtain ⟨q1, q2, q3, q4, q5, q6⟩ := Solution.build_route I s ra c
  obtain ⟨e1, e2, e3, e4, e5, _, _⟩ := Solution.build_scalars I s ra c
  have hr0 : (Solution.build_one_customer_route I s ra c).1 ≠ 0 := by omega
  have hnone : ∀ u, u ≠ 0 →
      (s.customers_list u).route_ptr ≠ (Solution.build_one_customer_route I s ra c).1 := by
    intro u hu h
    have := ((hR.routes _).mem_iff u hu).2 ⟨h, hr0⟩
    rw [pa] at this
    exact absurd this (List.not_mem_nil u)
  exact
    { routes := fun r2 => by
        by_cases e : r2 = (Solution.build_one_customer_route I s ra c).1
        · rw [e, upd_same]
          exact
            { present_iff := by simp [q5]
              cycle := fun _ => by
                apply IsCycle_of_head
                simp only [Seg_nil, lastFrom_nil, Solution.get_next_vertex_zero,
                  Solution.get_prev_vertex_zero, Solution.get_cost_prev_vertex_zero,
                  Solution.get_next_vertex_ne _ _ hc0, Solution.get_prev_vertex_ne _ _ hc0,
                  Solution.get_cost_prev_vertex_ne _ _ hc0, q1, q2, q6, b1, b2, b4, true_and,
                  and_true]
                exact hsym.1 0 c
              nodup := by simp [hc0.symm]
              range := fun u hu => by
                simp only [List.mem_cons, List.mem_singleton, List.not_mem_nil, or_false] at hu
                rcases hu with rfl | rfl <;> omega
              mem_iff := fun u h0 => by
                by_cases euc : u = c
                · subst euc; simp [h0, b3, hr0]
                · have := (Solution.build_customers_list I s ra c u euc).2.2.1
                  rw [this]
                  simp only [List.mem_cons, h0, euc, List.not_mem_nil, or_false, false_iff,
                    not_and, not_not]
                  intro h
                  exact absurd h (hnone u h0)
              load := fun _ => by rw [q3]; simp [loadOf, custs, hc0]
              size := fun _ => by rw [q4]; simp [sizeOf, custs, hc0]
              missing := fun _ h0 => absurd (by simp) h0 }
        · rw [upd_other _ _ _ _ e]
          refine RouteRep_frame (hR.routes r2) (Solution.build_routes_list I s ra c r2 e) ?_ ?_
          · intro u hu h0
            refine Solution.build_customers_list I s ra c u ?_
            rintro rfl
            have := ((hR.routes r2).mem_iff u h0).1 hu
            rw [hun] at this
            exact this.2 this.1.symm
          · intro u h0 hu hp
            by_contra hr2
            by_cases euc : u = c
            · subst euc; rw [b3] at hp; exact e hp.symm
            · rw [(Solution.build_customers_list I s ra c u euc).2.2.1] at hp
              exact hu (((hR.routes r2).mem_iff u h0).2 ⟨hp, hr2⟩)
      bound := fun r2 h => by
        rw [e2]
        by_cases e : r2 = (Solution.build_one_customer_route I s ra c).1
        · rw [e]; exact ⟨pb, pc⟩
        · rw [upd_other _ _ _ _ e] at h; exact hR.bound r2 h
      unserved := fun v h1 h2 h3 => by
        by_cases euc : v = c
        · subst euc; rw [b3] at h3; exact absurd h3 hr0
        · obtain ⟨c1, c2, c3, _⟩ := Solution.build_customers_list I s ra c v euc
          rw [c1, c2]; rw [c3] at h3
          exact hR.unserved v h1 h2 h3
      pool_le := by rw [e3, e4]; omega
      pool_absent := fun i h1 h2 => by
        rw [e3] at h1; rw [e4] at h2; rw [e5, e2]
        obtain ⟨a, b, c'⟩ := hR.pool_absent i (by omega) h2
        refine ⟨?_, b, c'⟩
        rw [upd_other _ _ _ _ ?_]
        · exact a
        · rw [Solution.build_route_eq]
          intro h
          have := hR.pool_inj i s.routes_pool.begin (by omega) h2 (le_refl _) hpool h
          omega
      pool_inj := fun i j h1 h2 h3 h4 h5 => by
        rw [e3] at h1 h3; rw [e4] at h2 h4; rw [e5] at h5
        exact hR.pool_inj i j (by omega) h2 (by omega) h4 h5
      pool_nonneg := by rw [e3]; have := hR.pool_nonneg; omega
      pool_cap := by rw [e4, e2]; exact hR.pool_cap }

theorem build_costOK (ra : Bool) {c : Int} (hsym : CostSym I) (hR : Rep I s A)
    (hC : CostOK I s A) (hpool : s.routes_pool.begin < s.routes_pool.capacity) :
    CostOK I (Solution.build_one_customer_route I s ra c).2
      (upd A (Solution.build_one_customer_route I s ra c).1 [0, c]) := by
  obtain ⟨pa, _, pc⟩ := hR.pool_absent _ (le_refl _) hpool
  rw [← Solution.build_route_eq I s ra c] at pa pc
  obtain ⟨e1, e2, _⟩ := Solution.build_scalars I s ra c
  refine CostOK_update hC pc e2 ?_
  rw [e1, pa, cycCost_head]
  simp only [segCost_nil, lastFrom_nil, cycCost]
  rw [hsym.1 c 0]
  ring

/-- Releasing the empty route `r` (cycle `[0]`) removes it from the description. -/
theorem remove_route_rep (ra : Bool) {r : Nat} (hR : Rep I s A) (hA : A r = [0]) :
    Rep I (s.remove_route ra r) (upd A r []) := by
  have hAr : A r ≠ [] := by rw [hA]; simp
  obtain ⟨hb1, hb2⟩ := hR.bound r hAr
  obtain ⟨q1, q2, q3, q4, q5⟩ := Solution.remove_route_self s ra r
  obtain ⟨e1, e2, e3, _, _⟩ := Solution.remove_route_scalars s ra r
  have hcl := Solution.remove_route_customers_list s ra r
  have key : ∀ r2, upd A r [] r2 ≠ [] → r2 ≠ r ∧ A r2 ≠ [] := by
    intro r2 h
    by_cases e : r2 = r
    · subst e; rw [upd_same] at h; exact absurd rfl h
    · rw [upd_other _ _ _ _ e] at h; exact ⟨e, h⟩
  have hpa : ∀ i, s.routes_pool.begin ≤ i → i < s.routes_pool.capacity →
      s.routes_pool.array i ≠ r := by
    intro i h1 h2 h
    have := (hR.pool_absent i h1 h2).1
    rw [h] at this
    exact hAr this
  exact
    { routes := fun r2 => by
        by_cases e : r2 = r
        · subst e
          rw [upd_same]
          exact
            { present_iff := by simp [q1]
              cycle := fun h => absurd rfl h
              nodup := List.nodup_nil
              range := fun u hu => absurd hu (List.not_mem_nil u)
              mem_iff := fun u h0 => by
                rw [hcl]
                have := (hR.routes r2).mem_iff u h0
                rw [hA] at this
                simp only [List.mem_singleton, h0, false_iff] at this
                simp only [List.not_mem_nil, false_iff]
                exact this
              load := fun h => absurd rfl h
              size := fun h => absurd rfl h
              missing := fun h => absurd rfl h }
        · rw [upd_other _ _ _ _ e]
          refine RouteRep_frame (hR.routes r2) (Solution.remove_route_routes_list s ra r r2 e) ?_ ?_
          · intro u _ _
            rw [hcl]
            exact ⟨rfl, rfl, rfl, rfl⟩
          · intro u h0 hu hp
            by_contra hr2
            rw [hcl] at hp
            exact hu (((hR.routes r2).mem_iff u h0).2 ⟨hp, hr2⟩)
      bound := fun r2 h => by rw [e2]; exact hR.bound r2 (key r2 h).2
      unserved := fun v h1 h2 h3 => by
        rw [hcl] at h3 ⊢
        exact hR.unserved v h1 h2 h3
      pool_le := by
        rw [e3]
        have := hR.pool_le
        simp only [FixedSizeValueStack.push]
        omega
      pool_absent := fun i h1 h2 => by
        rw [e3] at h1 h2 ⊢
        rw [e2]
        simp only [FixedSizeValueStack.push] at h1 h2 ⊢
        by_cases e : i = s.routes_pool.begin - 1
        · rw [e, upd_same, upd_same]
          exact ⟨rfl, hb1, hb2⟩
        · rw [upd_other _ _ _ _ e]
          obtain ⟨a, b, c⟩ := hR.pool_absent i (by omega) h2
          refine ⟨?_, b, c⟩
          rw [upd_other _ _ _ _ (hpa i (by omega) h2)]
          exact a
      pool_inj := fun i j h1 h2 h3 h4 h5 => by
        rw [e3] at h1 h2 h3 h4 h5
        simp only [FixedSizeValueStack.push] at h1 h2 h3 h4 h5
        by_cases ei : i = s.routes_pool.begin - 1 <;> by_cases ej : j = s.routes_pool.begin - 1
        · omega
        · rw [ei, upd_same, upd_other _ _ _ _ ej] at h5
          exact absurd h5.symm (hpa j (by omega) h4)
        · rw [ej, upd_same, upd_other _ _ _ _ ei] at h5
          exact absurd h5 (hpa i (by omega) h2)
        · rw [upd_other _ _ _ _ ei, upd_other _ _ _ _ ej] at h5
          exact hR.pool_inj i j (by omega) h2 (by omega) h4 h5
      pool_nonneg := by
        rw [e3]
        have := hR.pool_begin_pos hAr
        simp only [FixedSizeValueStack.push]
        omega
      pool_cap := by
        rw [e3, e2]
        simp only [FixedSizeValueStack.push]
        exact hR.pool_cap }

theorem remove_route_costOK (ra : Bool) {r : Nat} (hsym : CostSym I) (hR : Rep I s A)
    (hC : CostOK I s A) (hA : A r = [0]) :
    CostOK I (s.remove_route ra r) (upd A r []) := by
  have hAr : A r ≠ [] := by rw [hA]; simp
  obtain ⟨e1, e2, _⟩ := Solution.remove_route_scalars s ra r
  refine CostOK_update hC (hR.bound r hAr).2 e2 ?_
  rw [e1, hA, cycCost_single, hsym.2 0]
  simp [cycCost]

end BuildRep

/-! ## Effect of `reverse_route_path` -/

namespace Solution

section ReverseStep

variable (s : Solution) (r : Nat) (curr : Int)

theorem reverse_step_snd : (s.reverse_step r curr).2 = s.get_next_vertex r curr := by
  simp [reverse_step, get_next_vertex]

theorem reverse_step_next (u : Int) :
    (s.reverse_step r curr).1.get_next_vertex r u =
      if u = curr then s.get_prev_vertex r curr else s.get_next_vertex r u := by
  by_cases hc : curr = 0
  · subst hc
    simp only [reverse_step, if_true]
    simp [get_next_vertex, get_prev_vertex]
    split_ifs <;> first | rfl | omega | simp_all
  · simp only [reverse_step, hc, if_false]
    simp [get_next_vertex, get_prev_vertex, hc]
    split_ifs <;> first | rfl | omega | simp_all

theorem reverse_step_prev (u : Int) :
    (s.reverse_step r curr).1.get_prev_vertex r u =
      if u = curr then s.get_next_vertex r curr else s.get_prev_vertex r u := by
  by_cases hc : curr = 0
  · subst hc
    simp only [reverse_step, if_true]
    simp [get_next_vertex, get_prev_vertex]
    split_ifs <;> first | rfl | omega | simp_all
  · simp only [reverse_step, hc, if_false]
    simp [get_next_vertex, get_prev_vertex, hc]
    split_ifs <;> first | rfl | omega | simp_all

theorem reverse_step_cc (hdep : curr = 0 → s.get_next_vertex r 0 ≠ 0) (u : Int) :
    (s.reverse_step r curr).1.get_cost_prev_vertex r u =
      if u = curr then s.get_cost_prev_vertex r (s.get_next_vertex r curr)
      else s.get_cost_prev_vertex r u := by
  by_cases hc : curr = 0
  · have h := hdep hc
    subst hc
    simp only [get_next_vertex, if_true] at h
    simp only [reverse_step, if_true]
    simp [get_next_vertex, get_cost_prev_vertex, h]
    split_ifs <;> first | rfl | omega | simp_all
  · simp only [reverse_step, hc, if_false]
    simp [get_next_vertex, get_cost_prev_vertex, hc]
    split_ifs <;> first | rfl | omega | simp_all

theorem reverse_step_customers_list (u : Int) (hu : u ≠ curr) :
    (s.reverse_step r curr).1.customers_list u = s.customers_list u := by
  by_cases hc : curr = 0
  · subst hc
    simp only [reverse_step, if_true]
    simp
  · simp only [reverse_step, hc, if_false]
    cases h : s.customers_list u
    cases h2 : ((((s.cache_insert curr).set_customer_prev curr
      ((s.cache_insert curr).get_next_vertex r curr)).set_customer_next curr
      ((s.cache_insert curr).get_prev_vertex r curr)).set_customer_c_prev_curr curr
      ((s.cache_insert curr).get_cost_prev_vertex r
        ((s.cache_insert curr).get_next_vertex r curr))).customers_list u
    have e1 := congrArg CustomerNode.next h2
    have e2 := congrArg CustomerNode.prev h2
    have e3 := congrArg CustomerNode.route_ptr h2
    have e4 := congrArg CustomerNode.load_after h2
    have e5 := congrArg CustomerNode.load_before h2
    have e6 := congrArg CustomerNode.c_prev_curr h2
    simp [hu, h] at e1 e2 e3 e4 e5 e6
    simp [e1, e2, e3, e4, e5, e6]

theorem reverse_step_route_ptr (u : Int) :
    ((s.reverse_step r curr).1.customers_list u).route_ptr = (s.customers_list u).route_ptr := by
  by_cases hc : curr = 0
  · subst hc
    simp only [reverse_step, if_true]
    simp
  · simp only [reverse_step, hc, if_false]
    simp

theorem reverse_step_routes_list (r2 : Nat) (hr : r2 ≠ r) :
    (s.reverse_step r curr).1.routes_list r2 = s.routes_list r2 := by
  by_cases hc : curr = 0
  · subst hc
    simp only [reverse_step, if_true]
    cases h : s.routes_list r2
    cases h2 : ((((s.cache_insert 0).set_route_last_customer r
      ((s.cache_insert 0).get_next_vertex r 0)).set_route_first_customer r
      ((s.cache_insert 0).get_prev_vertex r 0)).set_route_c_prev_curr r
      ((s.cache_insert 0).customers_list ((s.cache_insert 0).get_next_vertex r 0)).c_prev_curr
      ).routes_list r2
    have e1 := congrArg RouteNode.first_customer h2
    have e2 := congrArg RouteNode.last_customer h2
    have e3 := congrArg RouteNode.load h2
    have e4 := congrArg RouteNode.next h2
    have e5 := congrArg RouteNode.prev h2
    have e6 := congrArg RouteNode.size h2
    have e7 := congrArg RouteNode.needs_cumulative_load_update h2
    have e8 := congrArg RouteNode.in_solution h2
    have e9 := congrArg RouteNode.c_prev_curr h2
    simp [hr, h] at e1 e2 e3 e4 e5 e6 e7 e8 e9
    simp [e1, e2, e3, e4, e5, e6, e7, e8, e9]
  · simp only [reverse_step, hc, if_false]
    simp

theorem reverse_step_route_self :
    ((s.reverse_step r curr).1.routes_list r).load = (s.routes_list r).load ∧
    ((s.reverse_step r curr).1.routes_list r).size = (s.routes_list r).size ∧
    ((s.reverse_step r curr).1.routes_list r).in_solution = (s.routes_list r).in_solution := by
  by_cases hc : curr = 0
  · subst hc
    simp only [reverse_step, if_true]
    simp
  · simp only [reverse_step, hc, if_false]
    simp

theorem reverse_step_scalars :
    (s.reverse_step r curr).1.solution_cost = s.solution_cost ∧
    (s.reverse_step r curr).1.routes_pool = s.routes_pool ∧
    (s.reverse_step r curr).1.max_number_routes = s.max_number_routes ∧
    (s.reverse_step r curr).1.depot_node = s.depot_node ∧
    (s.reverse_step r curr).1.do_list1 = s.do_list1 ∧
    (s.reverse_step r curr).1.undo_list1 = s.undo_list1 := by
  by_cases hc : curr = 0
  · subst hc
    simp only [reverse_step, if_true]
    simp
  · simp only [reverse_step, hc, if_false]
    simp

end ReverseStep

end Solution

section NextChainLemmas

variable {nx nx2 : Int → Int}

theorem NextChain_congr (x : Int) (l : List Int) (stop : Int)
    (h : ∀ u ∈ x :: l, nx2 u = nx u) (hc : NextChain nx x l stop) : NextChain nx2 x l stop := by
  induction l generalizing x with
  | nil =>
    simp only [NextChain] at hc ⊢
    rw [h x (by simp)]; exact hc
  | cons y t ih =>
    simp only [NextChain] at hc ⊢
    refine ⟨by rw [h x (by simp)]; exact hc.1, ih y (fun u hu => h u (by simp [hu])) hc.2⟩

theorem NextChain_mem (x : Int) (l : List Int) (stop : Int) (hc : NextChain nx x l stop) :
    (∀ u ∈ initFrom x l, nx u ∈ l) ∧ nx (lastFrom x l) = stop := by
  induction l generalizing x with
  | nil => exact ⟨by simp, hc⟩
  | cons y t ih =>
    simp only [NextChain] at hc
    obtain ⟨i1, i2⟩ := ih y hc.2
    refine ⟨?_, i2⟩
    intro u hu
    simp only [initFrom_cons, List.mem_cons] at hu
    rcases hu with rfl | hu
    · rw [hc.1]; simp
    · exact List.mem_cons_of_mem _ (i1 u hu)

theorem NextChain_of_Seg {cost : Int → Int → Int} {pv cc : Int → Int} (x : Int) (l : List Int)
    (stop : Int) (h : Seg cost nx pv cc x l) (hs : nx (lastFrom x l) = stop) :
    NextChain nx x l stop := by
  induction l generalizing x with
  | nil => exact hs
  | cons y t ih =>
    obtain ⟨h1, _, _, h4⟩ := h
    exact ⟨h1, ih y h4 hs⟩

end NextChainLemmas

namespace Solution

theorem reverse_loop_spec (r : Nat) (stop : Int) :
    ∀ (rem : List Int) (curr : Int) (s : Solution) (fuel : Nat), rem.length < fuel →
      NextChain (s.get_next_vertex r) curr rem stop → (curr :: rem).Nodup → stop ∉ rem →
      ((0 : Int) ∈ curr :: rem → s.get_next_vertex r 0 ≠ 0) →
      ∃ s2, reverse_loop r stop fuel s curr = some s2 ∧
        Reversed s s2 r (curr :: rem) (lastFrom curr rem) ∧
        s2.do_list1 = s.do_list1 ∧ s2.undo_list1 = s.undo_list1 := by
  intro rem
  induction rem with
  | nil =>
    intro curr s fuel hf hc _ _ hdep
    obtain ⟨f, rfl⟩ : ∃ f, fuel = f + 1 := ⟨fuel - 1, by simp at hf; omega⟩
    simp only [NextChain] at hc
    obtain ⟨a1, a2, a3⟩ := reverse_step_route_self s r curr
    obtain ⟨b1, b2, b3, b4, b5, b6⟩ := reverse_step_scalars s r curr
    refine ⟨(s.reverse_step r curr).1, ?_, ?_, b5, b6⟩
    · simp [reverse_loop, reverse_step_snd, hc]
    · exact
        { nx := fun u => by
            rw [reverse_step_next]
            by_cases h : u = curr
            · subst h; simp
            · simp [h]
          pv := fun u => by
            rw [reverse_step_prev]
            by_cases h : u = curr
            · subst h; simp
            · simp [h]
          cc := fun u hu => by
            simp only [lastFrom_nil] at hu
            rw [reverse_step_cc s r curr (fun h => hdep (by simp [h]))]
            simp [hu]
          custs := fun u hu => reverse_step_customers_list s r curr u (by simpa using hu)
          route_ptr := reverse_step_route_ptr s r curr
          routes := reverse_step_routes_list s r curr
          load := a1, size := a2, in_solution := a3, cost := b1, pool := b2, maxr := b3
          depot := b4 }
  | cons y t ih =>
    intro curr s fuel hf hc hnd hstop hdep
    obtain ⟨f, rfl⟩ : ∃ f, fuel = f + 1 := ⟨fuel - 1, by simp at hf; omega⟩
    simp only [NextChain] at hc
    obtain ⟨hc1, hc2⟩ := hc
    have hcy : curr ∉ y :: t := (List.nodup_cons.1 hnd).1
    have hnd2 : (y :: t).Nodup := (List.nodup_cons.1 hnd).2
    have hys : y ≠ stop := by rintro rfl; exact hstop (by simp)
    have hne : ∀ u ∈ y :: t, u ≠ curr := fun u hu e => hcy (e ▸ hu)
    have hdep1 : curr = 0 → s.get_next_vertex r 0 ≠ 0 := fun h => hdep (by simp [h])
    obtain ⟨s2, hs2, hrev, hl1, hl2⟩ := ih y (s.reverse_step r curr).1 f (by simp at hf ⊢; omega)
      (NextChain_congr y t stop (fun u hu => by
        rw [reverse_step_next, if_neg (hne u hu)]) hc2)
      hnd2 (fun h => hstop (List.mem_cons_of_mem _ h))
      (fun h0 => by
        rw [reverse_step_next, if_neg (hne 0 h0)]
        exact hdep (List.mem_cons_of_mem _ h0))
    obtain ⟨a1, a2, a3⟩ := reverse_step_route_self s r curr
    obtain ⟨b1, b2, b3, b4, b5, b6⟩ := reverse_step_scalars s r curr
    refine ⟨s2, ?_, ?_, by rw [hl1, b5], by rw [hl2, b6]⟩
    · simp only [reverse_loop, reverse_step_snd, hc1, ne_eq, hys, not_false_eq_true, if_true]
      exact hs2
    · obtain ⟨m1, _⟩ := NextChain_mem y t stop hc2
      exact
        { nx := fun u => by
            rw [hrev.nx, reverse_step_next, reverse_step_prev]
            by_cases h1 : u ∈ y :: t
            · simp [h1, hne u h1]
            · by_cases h2 : u = curr
              · subst h2; simp [h1]
              · simp only [h1, if_false, h2, List.mem_cons, false_or]
          pv := fun u => by
            rw [hrev.pv, reverse_step_next, reverse_step_prev]
            by_cases h1 : u ∈ y :: t
            · simp [h1, hne u h1]
            · by_cases h2 : u = curr
              · subst h2; simp [h1]
              · simp only [h1, if_false, h2, List.mem_cons, false_or]
          cc := fun u hu => by
            simp only [lastFrom_cons] at hu
            rw [hrev.cc u hu]
            by_cases h1 : u ∈ y :: t
            · have h3 : u ∈ initFrom y t := by
                have := initFrom_append_lastFrom y t
                have h4 : u ∈ initFrom y t ++ [lastFrom y t] := by rw [this]; exact h1
                simp only [List.mem_append, List.mem_singleton] at h4
                rcases h4 with h4 | h4
                · exact h4
                · exact absurd h4 hu
              have h5 : s.get_next_vertex r u ≠ curr := by
                intro e
                have := m1 u h3
                rw [e] at this
                exact hcy (List.mem_cons_of_mem _ this)
              rw [if_pos h1, reverse_step_next, if_neg (hne u h1),
                reverse_step_cc s r curr hdep1, if_neg h5]
              simp [h1]
            · rw [if_neg h1, reverse_step_cc s r curr hdep1]
              by_cases h2 : u = curr
              · subst h2; simp
              · simp only [h2, if_false, List.mem_cons, false_or]
                simp only [List.mem_cons] at h1
                simp [h1]
          custs := fun u hu => by
            simp only [List.mem_cons, not_or] at hu
            rw [hrev.custs u (by simp only [List.mem_cons, not_or]; exact hu.2),
              reverse_step_customers_list s r curr u hu.1]
          route_ptr := fun u => by rw [hrev.route_ptr, reverse_step_route_ptr]
          routes := fun r2 hr => by rw [hrev.routes r2 hr, reverse_step_routes_list s r curr r2 hr]
          load := by rw [hrev.load, a1]
          size := by rw [hrev.size, a2]
          in_solution := by rw [hrev.in_solution, a3]
          cost := by rw [hrev.cost, b1]
          pool := by rw [hrev.pool, b2]
          maxr := by rw [hrev.maxr, b3]
          depot := by rw [hrev.depot, b4] }

end Solution

/-! ## Reversed paths -/

section ReversePaths

variable {cost : Int → Int → Int} {nx pv cc : Int → Int}

theorem reverse_cons_eq (x : Int) (l : List Int) :
    (x :: l).reverse = lastFrom x l :: (initFrom x l).reverse := by
  conv_lhs => rw [← initFrom_append_lastFrom x l]
  simp

theorem lastFrom_reverse_initFrom (x : Int) (l : List Int) :
    lastFrom (lastFrom x l) (initFrom x l).reverse = x := by
  cases l with
  | nil => rfl
  | cons y t => simp

theorem mem_initFrom_reverse (x : Int) (l : List Int) (u : Int)
    (h : u ∈ (initFrom x l).reverse) : u ∈ x :: l :=
  initFrom_subset x l u (List.mem_reverse.1 h)

theorem Seg_reverse (hsym : ∀ i j, cost i j = cost j i) (x : Int) (l : List Int)
    (h : Seg cost nx pv cc x l) :
    Seg cost pv nx (fun u => cc (nx u)) (lastFrom x l) (initFrom x l).reverse := by
  induction l generalizing x with
  | nil => trivial
  | cons y t ih =>
    obtain ⟨h1, h2, h3, h4⟩ := h
    simp only [lastFrom_cons, initFrom_cons, List.reverse_cons]
    rw [Seg_append]
    refine ⟨ih y h4, ?_⟩
    rw [lastFrom_reverse_initFrom]
    simp only [Seg_cons, Seg_nil, and_true]
    refine ⟨h2, h1, ?_⟩
    rw [h1, h3]
    exact hsym x y

theorem segCost_reverse (hsym : ∀ i j, cost i j = cost j i) (x : Int) (l : List Int) :
    segCost cost (lastFrom x l) (initFrom x l).reverse = segCost cost x l := by
  induction l generalizing x with
  | nil => rfl
  | cons y t ih =>
    simp only [lastFrom_cons, initFrom_cons, List.reverse_cons]
    rw [segCost_append, ih y, lastFrom_reverse_initFrom]
    simp only [segCost_cons, segCost_nil]
    rw [hsym y x]
    ring

/-- On a cycle of at least two distinct vertices no vertex is its own successor. -/
theorem IsCycle_next_ne {l : List Int} (h : IsCycle cost nx pv cc l) (hnd : l.Nodup)
    (hlen : 2 ≤ l.length) : ∀ u ∈ l, nx u ≠ u := by
  intro u hu
  obtain ⟨t, ht⟩ := exists_rotated_cons hu
  have h2 := IsCycle_isRotated ht h
  have hnd2 := ht.nodup_iff.1 hnd
  have hlen2 : 2 ≤ (u :: t).length := by rw [← ht.perm.length_eq]; exact hlen
  cases t with
  | nil => simp at hlen2
  | cons y t2 =>
    have := (IsCycle_head h2).1
    rw [this]
    rintro rfl
    exact (List.nodup_cons.1 hnd2).1 (by simp)

end ReversePaths

namespace Solution

section SetterGetters

variable (s : Solution) (r : Nat) (x y : Int)

theorem set_next_vertex_ptr_get_next (u : Int) :
    (s.set_next_vertex_ptr r x y).get_next_vertex r u =
      if u = x then y else s.get_next_vertex r u := by
  simp [get_next_vertex]
  split_ifs <;> first | rfl | omega | simp_all

theorem set_next_vertex_ptr_get_prev (r2 : Nat) (u : Int) :
    (s.set_next_vertex_ptr r x y).get_prev_vertex r2 u = s.get_prev_vertex r2 u := by
  simp [get_prev_vertex]

theorem set_next_vertex_ptr_get_cc (r2 : Nat) (u : Int) :
    (s.set_next_vertex_ptr r x y).get_cost_prev_vertex r2 u = s.get_cost_prev_vertex r2 u := by
  simp [get_cost_prev_vertex]

theorem set_prev_vertex_ptr_get_prev (u : Int) :
    (s.set_prev_vertex_ptr r x y).get_prev_vertex r u =
      if u = x then y else s.get_prev_vertex r u := by
  simp [get_prev_vertex]
  split_ifs <;> first | rfl | omega | simp_all

theorem set_prev_vertex_ptr_get_next (r2 : Nat) (u : Int) :
    (s.set_prev_vertex_ptr r x y).get_next_vertex r2 u = s.get_next_vertex r2 u := by
  simp [get_next_vertex]

theorem set_prev_vertex_ptr_get_cc (r2 : Nat) (u : Int) :
    (s.set_prev_vertex_ptr r x y).get_cost_prev_vertex r2 u = s.get_cost_prev_vertex r2 u := by
  simp [get_cost_prev_vertex]

theorem set_cost_prev_vertex_get_cc (u : Int) :
    (s.set_cost_prev_vertex r x y).get_cost_prev_vertex r u =
      if u = x then y else s.get_cost_prev_vertex r u := by
  simp [get_cost_prev_vertex]
  split_ifs <;> first | rfl | omega | simp_all

theorem set_cost_prev_vertex_get_next (r2 : Nat) (u : Int) :
    (s.set_cost_prev_vertex r x y).get_next_vertex r2 u = s.get_next_vertex r2 u := by
  simp [get_next_vertex]

theorem set_cost_prev_vertex_get_prev (r2 : Nat) (u : Int) :
    (s.set_cost_prev_vertex r x y).get_prev_vertex r2 u = s.get_prev_vertex r2 u := by
  simp [get_prev_vertex]

end SetterGetters

/-- The state `reverse_route_path` returns once its loop has produced `s2`. -/
theorem reverse_route_path_eq (I : Instance) (s : Solution) (ra : Bool) (r : Nat) (a b : Int)
    (fuel : Nat) (s2 : Solution)
    (h : reverse_loop r (s.get_next_vertex r b) fuel
      (((s.record ra (Action.reverse_route_path r a b) (Action.reverse_route_path r b a)
        ).cache_insert (s.get_prev_vertex r a)).cache_insert (s.get_next_vertex r b)) a = some s2) :
    reverse_route_path I s ra r a b fuel =
      some (((if b = s.get_prev_vertex r a ∧ a = s.get_next_vertex r b then
          s2.set_cost_prev_vertex r b (s.get_cost_prev_vertex r a)
        else
          (((((s2.set_next_vertex_ptr r a (s.get_next_vertex r b)).set_next_vertex_ptr r
            (s.get_prev_vertex r a) b).set_prev_vertex_ptr r b (s.get_prev_vertex r a)
            ).set_cost_prev_vertex r b (I.cost (s.get_prev_vertex r a) b)).set_prev_vertex_ptr r
            (s.get_next_vertex r b) a).set_cost_prev_vertex r (s.get_next_vertex r b)
            (I.cost (s.get_next_vertex r b) a)).add_cost
        (- I.cost (s.get_prev_vertex r a) a - I.cost b (s.get_next_vertex r b)
          + I.cost (s.get_prev_vertex r a) b + I.cost (s.get_next_vertex r b) a)
        ).set_route_needs_cumulative_load_update r true) := by
  have e1 : ∀ u, (s.record ra (Action.reverse_route_path r a b)
      (Action.reverse_route_path r b a)).get_next_vertex r u = s.get_next_vertex r u := by
    intro u; simp [get_next_vertex]
  have e2 : ∀ u, (s.record ra (Action.reverse_route_path r a b)
      (Action.reverse_route_path r b a)).get_prev_vertex r u = s.get_prev_vertex r u := by
    intro u; simp [get_prev_vertex]
  have e3 : ∀ u, (s.record ra (Action.reverse_route_path r a b)
      (Action.reverse_route_path r b a)).get_cost_prev_vertex r u =
        s.get_cost_prev_vertex r u := by
    intro u; simp [get_cost_prev_vertex]
  simp only [reverse_route_path, e1, e2, e3, h]

end Solution

theorem Reversed_of_record {s s2 : Solution} {ra : Bool} {d u : Action} {p q : Int} {r : Nat}
    {X : List Int} {last : Int}
    (h : Reversed (((s.record ra d u).cache_insert p).cache_insert q) s2 r X last) :
    Reversed s s2 r X last :=
  { nx := fun v => by
      have := h.nx v
      simpa [Solution.get_next_vertex, Solution.get_prev_vertex] using this
    pv := fun v => by
      have := h.pv v
      simpa [Solution.get_next_vertex, Solution.get_prev_vertex] using this
    cc := fun v hv => by
      have := h.cc v hv
      simpa [Solution.get_next_vertex, Solution.get_cost_prev_vertex] using this
    custs := fun v hv => by
      have := h.custs v hv
      simpa using this
    route_ptr := fun v => by
      have := h.route_ptr v
      simpa using this
    routes := fun r2 hr => by
      have := h.routes r2 hr
      simpa using this
    load := by simpa using h.load
    size := by simpa using h.size
    in_solution := by simpa using h.in_solution
    cost := by simpa using h.cost
    pool := by simpa using h.pool
    maxr := by simpa using h.maxr
    depot := by simpa using h.depot }

section ReverseRep

variable {I : Instance} {s : Solution} {A : Nat → List Int} {r : Nat} {a b : Int}
  {xs ys : List Int}

/-- The loop of `reverse_route_path`, run on a represented route whose cycle is
`a :: (xs ++ ys)` with `b` the last vertex of `a :: xs`, terminates and swaps the links of
`a :: xs`. -/
theorem reverse_loop_of_rep (ra : Bool) {fuel : Nat} (hR : Rep I s A)
    (hA : A r = a :: (xs ++ ys)) (hx : xs ≠ []) (hb : lastFrom a xs = b)
    (hf : xs.length < fuel) :
    ∃ s2, Solution.reverse_loop r (s.get_next_vertex r b) fuel
        (((s.record ra (Action.reverse_route_path r a b) (Action.reverse_route_path r b a)
          ).cache_insert (s.get_prev_vertex r a)).cache_insert (s.get_next_vertex r b)) a
        = some s2 ∧
      Reversed s s2 r (a :: xs) b ∧
      s2.do_list1 = (s.record ra (Action.reverse_route_path r a b)
        (Action.reverse_route_path r b a)).do_list1 ∧
      s2.undo_list1 = (s.record ra (Action.reverse_route_path r a b)
        (Action.reverse_route_path r b a)).undo_list1 := by
  have rr := hR.routes r
  rw [hA] at rr
  have hcyc := rr.cycle (by simp)
  have hnd := rr.nodup
  have hseg := hcyc
  rw [IsCycle_cons, List.append_assoc, Seg_append, hb] at hseg
  obtain ⟨hs1, hs2⟩ := hseg
  have hlen : 2 ≤ (a :: (xs ++ ys)).length := by
    cases xs with
    | nil => exact absurd rfl hx
    | cons x t => simp
  have hnext := IsCycle_next_ne hcyc hnd hlen
  have hfacts := IsCycle_facts hcyc
  have hstop : s.get_next_vertex r b ∉ xs := by
    cases ys with
    | nil =>
      simp only [List.nil_append, Seg_cons] at hs2
      rw [hs2.1]
      exact fun h => (List.nodup_cons.1 hnd).1 (List.mem_append_left _ h)
    | cons y t =>
      simp only [List.cons_append, Seg_cons] at hs2
      rw [hs2.1]
      intro h
      have := (List.nodup_cons.1 hnd).2
      exact (List.disjoint_of_nodup_append this) h (by simp)
  have hnd2 : (a :: xs).Nodup := by
    have h1 := List.nodup_cons.1 hnd
    exact List.nodup_cons.2 ⟨fun h => h1.1 (List.mem_append_left _ h), (List.nodup_append.1 h1.2).1⟩
  have e1 : ∀ u, (((s.record ra (Action.reverse_route_path r a b)
      (Action.reverse_route_path r b a)).cache_insert (s.get_prev_vertex r a)).cache_insert
      (s.get_next_vertex r b)).get_next_vertex r u = s.get_next_vertex r u := by
    intro u; simp [Solution.get_next_vertex]
  obtain ⟨s2, h1, h2, h3, h4⟩ := Solution.reverse_loop_spec r (s.get_next_vertex r b) xs a
    (((s.record ra (Action.reverse_route_path r a b) (Action.reverse_route_path r b a)
      ).cache_insert (s.get_prev_vertex r a)).cache_insert (s.get_next_vertex r b)) fuel hf
    (NextChain_congr a xs _ (fun u _ => e1 u)
      (NextChain_of_Seg a xs _ hs1 (by rw [hb])))
    hnd2 hstop
    (fun h0 => by
      rw [e1]
      exact hnext 0 (by
        simp only [List.mem_cons, List.mem_append] at h0 ⊢
        tauto))
  rw [hb] at h2
  exact ⟨s2, h1, Reversed_of_record h2, by simpa using h3, by simpa using h4⟩

end ReverseRep

namespace Solution

section Finish

variable (I : Instance) (s2 : Solution) (r : Nat) (a b pre stop : Int)

theorem reverse_finish_next (u : Int) :
    (reverse_finish I s2 r a b pre stop).get_next_vertex r u =
      if u = pre then b else if u = a then stop else s2.get_next_vertex r u := by
  simp [reverse_finish, get_next_vertex]
  split_ifs <;> first | rfl | omega | simp_all

theorem reverse_finish_prev (u : Int) :
    (reverse_finish I s2 r a b pre stop).get_prev_vertex r u =
      if u = stop then a else if u = b then pre else s2.get_prev_vertex r u := by
  simp [reverse_finish, get_prev_vertex]
  split_ifs <;> first | rfl | omega | simp_all

theorem reverse_finish_cc (u : Int) :
    (reverse_finish I s2 r a b pre stop).get_cost_prev_vertex r u =
      if u = stop then I.cost stop a else if u = b then I.cost pre b
      else s2.get_cost_prev_vertex r u := by
  simp [reverse_finish, get_cost_prev_vertex]
  split_ifs <;> first | rfl | omega | simp_all

theorem reverse_finish_customers_list (u : Int) (h1 : u ≠ a) (h2 : u ≠ b) (h3 : u ≠ pre)
    (h4 : u ≠ stop) :
    CustomerNode.agree ((reverse_finish I s2 r a b pre stop).customers_list u)
      (s2.customers_list u) := by
  simp [CustomerNode.agree, reverse_finish, h1, h2, h3, h4]

theorem reverse_finish_route_ptr (u : Int) :
    ((reverse_finish I s2 r a b pre stop).customers_list u).route_ptr =
      (s2.customers_list u).route_ptr := by
  simp [reverse_finish]

theorem reverse_finish_routes_list (r2 : Nat) (hr : r2 ≠ r) :
    RouteNode.agree ((reverse_finish I s2 r a b pre stop).routes_list r2) (s2.routes_list r2) := by
  simp [RouteNode.agree, reverse_finish, hr]

theorem reverse_finish_self :
    ((reverse_finish I s2 r a b pre stop).routes_list r).load = (s2.routes_list r).load ∧
    ((reverse_finish I s2 r a b pre stop).routes_list r).size = (s2.routes_list r).size ∧
    ((reverse_finish I s2 r a b pre stop).routes_list r).in_solution =
      (s2.routes_list r).in_solution := by
  simp [reverse_finish]

theorem reverse_finish_scalars :
    (reverse_finish I s2 r a b pre stop).solution_cost = s2.solution_cost +
      (- I.cost pre a - I.cost b stop + I.cost pre b + I.cost stop a) ∧
    (reverse_finish I s2 r a b pre stop).routes_pool = s2.routes_pool ∧
    (reverse_finish I s2 r a b pre stop).max_number_routes = s2.max_number_routes ∧
    (reverse_finish I s2 r a b pre stop).depot_node = s2.depot_node ∧
    (reverse_finish I s2 r a b pre stop).do_list1 = s2.do_list1 ∧
    (reverse_finish I s2 r a b pre stop).undo_list1 = s2.undo_list1 := by
  simp [reverse_finish]

variable (c0 : Int)

theorem reverse_finish_whole_next (u : Int) :
    (reverse_finish_whole I s2 r a b c0).get_next_vertex r u = s2.get_next_vertex r u := by
  simp [reverse_finish_whole, get_next_vertex]

theorem reverse_finish_whole_prev (u : Int) :
    (reverse_finish_whole I s2 r a b c0).get_prev_vertex r u = s2.get_prev_vertex r u := by
  simp [reverse_finish_whole, get_prev_vertex]

theorem reverse_finish_whole_cc (u : Int) :
    (reverse_finish_whole I s2 r a b c0).get_cost_prev_vertex r u =
      if u = b then c0 else s2.get_cost_prev_vertex r u := by
  simp [reverse_finish_whole, get_cost_prev_vertex]
  split_ifs <;> first | rfl | omega | simp_all

theorem reverse_finish_whole_customers_list (u : Int) (h2 : u ≠ b) :
    CustomerNode.agree ((reverse_finish_whole I s2 r a b c0).customers_list u)
      (s2.customers_list u) := by
  simp [CustomerNode.agree, reverse_finish_whole, h2]

theorem reverse_finish_whole_route_ptr (u : Int) :
    ((reverse_finish_whole I s2 r a b c0).customers_list u).route_ptr =
      (s2.customers_list u).route_ptr := by
  simp [reverse_finish_whole]

theorem reverse_finish_whole_routes_list (r2 : Nat) (hr : r2 ≠ r) :
    RouteNode.agree ((reverse_finish_whole I s2 r a b c0).routes_list r2) (s2.routes_list r2) := by
  simp [RouteNode.agree, reverse_finish_whole, hr]

theorem reverse_finish_whole_self :
    ((reverse_finish_whole I s2 r a b c0).routes_list r).load = (s2.routes_list r).load ∧
    ((reverse_finish_whole I s2 r a b c0).routes_list r).size = (s2.routes_list r).size ∧
    ((reverse_finish_whole I s2 r a b c0).routes_list r).in_solution =
      (s2.routes_list r).in_solution := by
  simp [reverse_finish_whole]

theorem reverse_finish_whole_scalars :
    (reverse_finish_whole I s2 r a b c0).solution_cost = s2.solution_cost +
      (- I.cost b a - I.cost b a + I.cost b b + I.cost a a) ∧
    (reverse_finish_whole I s2 r a b c0).routes_pool = s2.routes_pool ∧
    (reverse_finish_whole I s2 r a b c0).max_number_routes = s2.max_number_routes ∧
    (reverse_finish_whole I s2 r a b c0).depot_node = s2.depot_node ∧
    (reverse_finish_whole I s2 r a b c0).do_list1 = s2.do_list1 ∧
    (reverse_finish_whole I s2 r a b c0).undo_list1 = s2.undo_list1 := by
  simp [reverse_finish_whole]

end Finish

/-- General case: `reverse_route_path` is its loop followed by `reverse_finish`. -/
theorem reverse_route_path_general (I : Instance) (s : Solution) (ra : Bool) (r : Nat) (a b : Int)
    (fuel : Nat) (s2 : Solution)
    (h : reverse_loop r (s.get_next_vertex r b) fuel
      (((s.record ra (Action.reverse_route_path r a b) (Action.reverse_route_path r b a)
        ).cache_insert (s.get_prev_vertex r a)).cache_insert (s.get_next_vertex r b)) a = some s2)
    (hc : ¬ (b = s.get_prev_vertex r a ∧ a = s.get_next_vertex r b)) :
    reverse_route_path I s ra r a b fuel =
      some (reverse_finish I s2 r a b (s.get_prev_vertex r a) (s.get_next_vertex r b)) := by
  rw [reverse_route_path_eq I s ra r a b fuel s2 h, if_neg hc]
  rfl

/-- Contiguous case: `reverse_route_path` is its loop followed by `reverse_finish_whole`. -/
theorem reverse_route_path_whole (I : Instance) (s : Solution) (ra : Bool) (r : Nat) (a b : Int)
    (fuel : Nat) (s2 : Solution)
    (h : reverse_loop r (s.get_next_vertex r b) fuel
      (((s.record ra (Action.reverse_route_path r a b) (Action.reverse_route_path r b a)
        ).cache_insert (s.get_prev_vertex r a)).cache_insert (s.get_next_vertex r b)) a = some s2)
    (h1 : b = s.get_prev_vertex r a) (h2 : a = s.get_next_vertex r b) :
    reverse_route_path I s ra r a b fuel =
      some (reverse_finish_whole I s2 r a b (s.get_cost_prev_vertex r a)) := by
  rw [reverse_route_path_eq I s ra r a b fuel s2 h, if_pos ⟨h1, h2⟩]
  simp only [reverse_finish_whole, ← h1, ← h2]

end Solution

section ReverseRep2

variable {I : Instance} {s : Solution} {A : Nat → List Int} {r : Nat} {a b : Int}
  {xs : List Int}

theorem nodup_reverse_append {X Y : List Int} (h : (X ++ Y).Nodup) : (X.reverse ++ Y).Nodup :=
  ((List.reverse_perm X).append_right Y).nodup_iff.2 h

theorem mem_reverse_append {X Y : List Int} (u : Int) : u ∈ X.reverse ++ Y ↔ u ∈ X ++ Y := by
  simp

/-- The description of route `r` after the general case of `reverse_route_path`. -/
theorem reverse_general_routeRep {y : Int} {ys : List Int} {s2 : Solution}
    (hsym : CostSym I) (hR : Rep I s A)
    (hA : A r = a :: (xs ++ y :: ys)) (hb : lastFrom a xs = b)
    (hrev : Reversed s s2 r (a :: xs) b) :
    RouteRep I (Solution.reverse_finish I s2 r a b (lastFrom y ys) y) r
      ((a :: xs).reverse ++ y :: ys) := by
  have rr := hR.routes r
  rw [hA] at rr
  have hcyc := rr.cycle (by simp)
  have hnd := rr.nodup
  have hseg := hcyc
  rw [IsCycle_cons, List.append_assoc, Seg_append, hb] at hseg
  obtain ⟨hs1, hs2⟩ := hseg
  simp only [List.cons_append, Seg_cons] at hs2
  obtain ⟨n1, n2, n3, hs3⟩ := hs2
  rw [Seg_append] at hs3
  simp only [Seg_cons, Seg_nil, and_true] at hs3
  obtain ⟨hs4, m1, m2, m3⟩ := hs3
  have hnd1 := List.nodup_cons.1 hnd
  have hndX : (a :: xs).Nodup :=
    List.nodup_cons.2 ⟨fun h => hnd1.1 (List.mem_append_left _ h), (List.nodup_append.1 hnd1.2).1⟩
  have hndY : (y :: ys).Nodup := (List.nodup_append.1 hnd1.2).2.1
  have hdisj : ∀ u, u ∈ a :: xs → u ∈ y :: ys → False := by
    intro u h1 h2
    rcases List.mem_cons.1 h1 with e | e
    · exact hnd1.1 (e ▸ List.mem_append_right _ h2)
    · exact (List.disjoint_of_nodup_append hnd1.2) e h2
  have hbX : b ∈ a :: xs := hb ▸ lastFrom_mem a xs
  have hpY : lastFrom y ys ∈ y :: ys := lastFrom_mem y ys
  have enx := Solution.reverse_finish_next I s2 r a b (lastFrom y ys) y
  have epv := Solution.reverse_finish_prev I s2 r a b (lastFrom y ys) y
  have ecc := Solution.reverse_finish_cc I s2 r a b (lastFrom y ys) y
  obtain ⟨f1, f2, f3⟩ := Solution.reverse_finish_self I s2 r a b (lastFrom y ys) y
  have hl2eq : (a :: xs).reverse ++ y :: ys =
      b :: ((initFrom a xs).reverse ++ y :: ys) := by
    rw [reverse_cons_eq, hb]; rfl
  have hmem : ∀ u, u ∈ (a :: xs).reverse ++ y :: ys ↔ u ∈ a :: (xs ++ y :: ys) := by
    intro u; simp; tauto
  have hpX : lastFrom y ys ∉ a :: xs := fun h => hdisj _ h hpY
  have hyX : y ∉ a :: xs := fun h => hdisj _ h (by simp)
  have hlast : lastFrom b (initFrom a xs).reverse = a := by
    rw [← hb]; exact lastFrom_reverse_initFrom a xs
  have hndR : (b :: (initFrom a xs).reverse).Nodup := by
    have := List.nodup_reverse.2 hndX
    rwa [reverse_cons_eq, hb] at this
  have hR1 := Seg_reverse hsym.1 a xs hs1
  rw [hb] at hR1
  -- the reversed part
  have part1 : Seg I.cost
      ((Solution.reverse_finish I s2 r a b (lastFrom y ys) y).get_next_vertex r)
      ((Solution.reverse_finish I s2 r a b (lastFrom y ys) y).get_prev_vertex r)
      ((Solution.reverse_finish I s2 r a b (lastFrom y ys) y).get_cost_prev_vertex r)
      b (initFrom a xs).reverse := by
    refine Seg_frame b _ ?_ ?_ hR1
    · intro u hu
      have hu1 : u ∈ b :: (initFrom a xs).reverse := initFrom_subset _ _ u hu
      have hu2 : u ∈ a :: xs := by
        rcases List.mem_cons.1 hu1 with e | e
        · exact e ▸ hbX
        · exact mem_initFrom_reverse a xs u e
      have hua : u ≠ a := by
        intro e
        have := lastFrom_not_mem_initFrom b _ hndR
        rw [hlast] at this
        subst e
        exact this hu
      have hup : u ≠ lastFrom y ys := fun e => hpX (e ▸ hu2)
      rw [enx, if_neg hup, if_neg hua, hrev.nx, if_pos hu2]
    · intro u hu
      have hu2 : u ∈ a :: xs := mem_initFrom_reverse a xs u hu
      have hub : u ≠ b := by
        intro e
        have := lastFrom_not_mem_initFrom a xs hndX
        rw [hb] at this
        subst e
        exact this (List.mem_reverse.1 hu)
      have huy : u ≠ y := fun e => hyX (e ▸ hu2)
      rw [epv, ecc, if_neg huy, if_neg hub, if_neg huy, if_neg hub, hrev.pv,
        hrev.cc u hub, if_pos hu2, if_pos hu2]
      exact ⟨rfl, rfl⟩
  -- the untouched part
  have part2 : Seg I.cost
      ((Solution.reverse_finish I s2 r a b (lastFrom y ys) y).get_next_vertex r)
      ((Solution.reverse_finish I s2 r a b (lastFrom y ys) y).get_prev_vertex r)
      ((Solution.reverse_finish I s2 r a b (lastFrom y ys) y).get_cost_prev_vertex r)
      y ys := by
    refine Seg_frame y ys ?_ ?_ hs4
    · intro u hu
      have hu1 : u ∈ y :: ys := initFrom_subset y ys u hu
      have huX : u ∉ a :: xs := fun h => hdisj u h hu1
      have hup : u ≠ lastFrom y ys := by
        rintro rfl; exact lastFrom_not_mem_initFrom y ys hndY hu
      have hua : u ≠ a := fun e => huX (e ▸ List.mem_cons_self _ _)
      rw [enx, if_neg hup, if_neg hua, hrev.nx, if_neg huX]
    · intro u hu
      have hu1 : u ∈ y :: ys := List.mem_cons_of_mem _ hu
      have huX : u ∉ a :: xs := fun h => hdisj u h hu1
      have huy : u ≠ y := by rintro rfl; exact (List.nodup_cons.1 hndY).1 hu
      have hub : u ≠ b := fun e => huX (e ▸ hbX)
      rw [epv, ecc, if_neg huy, if_neg hub, if_neg huy, if_neg hub, hrev.pv,
        hrev.cc u hub, if_neg huX, if_neg huX]
      exact ⟨rfl, rfl⟩
  exact
    { present_iff := by
        rw [f3, hrev.in_solution, ← rr.present_iff]; simp
      cycle := fun _ => by
        rw [hl2eq, IsCycle_cons, List.append_assoc, Seg_append]
        refine ⟨part1, ?_⟩
        rw [hlast]
        simp only [List.cons_append, Seg_cons]
        have hap : a ≠ lastFrom y ys := fun e => hpX (e ▸ List.mem_cons_self _ _)
        have hby : b ≠ y := fun e => hyX (e ▸ hbX)
        refine ⟨?_, ?_, ?_, ?_⟩
        · rw [enx, if_neg hap]; simp
        · rw [epv]; simp
        · rw [ecc]; simp; exact hsym.1 y a
        · rw [Seg_append]
          simp only [Seg_cons, Seg_nil, and_true]
          refine ⟨part2, ?_, ?_, ?_⟩
          · rw [enx]; simp
          · rw [epv, if_neg hby]; simp
          · rw [ecc, if_neg hby]; simp
      nodup := by
        have : ((a :: xs) ++ (y :: ys)).Nodup := by simpa using hnd
        exact nodup_reverse_append this
      range := fun u hu => rr.range u ((hmem u).1 hu)
      mem_iff := fun u h0 => by
        rw [hmem, Solution.reverse_finish_route_ptr, hrev.route_ptr]
        exact rr.mem_iff u h0
      load := fun _ => by
        rw [f1, hrev.load, rr.load (by simp)]
        apply loadOf_perm
        exact ((List.reverse_perm (a :: xs)).append_right (y :: ys)).symm
      size := fun _ => by
        rw [f2, hrev.size, rr.size (by simp)]
        apply sizeOf_perm
        exact ((List.reverse_perm (a :: xs)).append_right (y :: ys)).symm
      missing := fun _ h0 => by
        have h0' : (0 : Int) ∉ a :: (xs ++ y :: ys) := fun h => h0 ((hmem 0).2 h)
        have hm := rr.missing (by simp) h0'
        have h0X : (0 : Int) ∉ a :: xs := by
          intro h; apply h0'
          simp only [List.mem_cons, List.mem_append] at h ⊢; tauto
        have h0Y : (0 : Int) ∉ y :: ys := by
          intro h; apply h0'
          simp only [List.mem_cons, List.mem_append] at h ⊢; tauto
        have a1 := enx 0
        have a2 := epv 0
        have k1 : (0 : Int) ≠ lastFrom y ys := fun e => h0Y (e ▸ hpY)
        have k2 : (0 : Int) ≠ a := fun e => h0X (e ▸ List.mem_cons_self _ _)
        have k3 : (0 : Int) ≠ y := fun e => h0Y (e ▸ List.mem_cons_self _ _)
        have k4 : (0 : Int) ≠ b := fun e => h0X (e ▸ hbX)
        rw [if_neg k1, if_neg k2, hrev.nx, if_neg h0X, Solution.get_next_vertex_zero,
          Solution.get_next_vertex_zero] at a1
        rw [if_neg k3, if_neg k4, hrev.pv, if_neg h0X, Solution.get_prev_vertex_zero,
          Solution.get_prev_vertex_zero] at a2
        rw [a1, a2]; exact hm }

/-- The invariant after the general case of `reverse_route_path`. -/
theorem reverse_general_finish_rep {y : Int} {ys : List Int} {s2 : Solution}
    (hsym : CostSym I) (hR : Rep I s A)
    (hA : A r = a :: (xs ++ y :: ys)) (hb : lastFrom a xs = b)
    (hrev : Reversed s s2 r (a :: xs) b) :
    Rep I (Solution.reverse_finish I s2 r a b (lastFrom y ys) y)
      (upd A r ((a :: xs).reverse ++ y :: ys)) := by
  have hrr := reverse_general_routeRep hsym hR hA hb hrev
  have hAr : A r ≠ [] := by rw [hA]; simp
  obtain ⟨_, g2, g3, _, _, _⟩ := Solution.reverse_finish_scalars I s2 r a b (lastFrom y ys) y
  have hbX : b ∈ a :: xs := hb ▸ lastFrom_mem a xs
  have hpY : lastFrom y ys ∈ y :: ys := lastFrom_mem y ys
  have hmem : ∀ u, u ∈ (a :: xs).reverse ++ y :: ys ↔ u ∈ a :: (xs ++ y :: ys) := by
    intro u; simp; tauto
  refine Rep_update hR hAr (by simp) (by rw [g2, hrev.pool]) (by rw [g3, hrev.maxr]) ?_ ?_ ?_ ?_
    hrr
  · intro r2 hr2
    have := Solution.reverse_finish_routes_list I s2 r a b (lastFrom y ys) y r2 hr2
    rw [hrev.routes r2 hr2] at this
    exact this
  · intro u _ h1 _
    rw [hA] at h1
    have hin : ∀ w, w ∈ a :: xs ∨ w ∈ y :: ys → u ≠ w := by
      intro w hw e
      apply h1
      rw [e]
      simp only [List.mem_cons, List.mem_append] at hw ⊢; tauto
    have := Solution.reverse_finish_customers_list I s2 r a b (lastFrom y ys) y u
      (hin a (Or.inl (by simp))) (hin b (Or.inl hbX)) (hin _ (Or.inr hpY))
      (hin y (Or.inr (by simp)))
    rw [hrev.custs u (fun h => hin u (Or.inl h) rfl)] at this
    exact this
  · intro u hu _ h1
    rw [hA] at h1
    exact absurd ((hmem u).1 hu) h1
  · intro u hu _ h1
    rw [hA] at hu
    exact absurd ((hmem u).2 hu) h1

theorem reverse_general_cost {y : Int} {ys : List Int} (hsym : CostSym I)
    (hb : lastFrom a xs = b) :
    - I.cost (lastFrom y ys) a - I.cost b y + I.cost (lastFrom y ys) b + I.cost y a =
      cycCost I.cost ((a :: xs).reverse ++ y :: ys) - cycCost I.cost (a :: (xs ++ y :: ys)) := by
  rw [reverse_cons_eq, hb]
  rw [show b :: (initFrom a xs).reverse ++ y :: ys = b :: ((initFrom a xs).reverse ++ y :: ys)
    from rfl, cycCost_eq, cycCost_eq]
  rw [segCost_append, segCost_append]
  have h1 := @segCost_reverse I.cost hsym.1 a xs
  rw [hb] at h1
  have hlast : lastFrom b (initFrom a xs).reverse = a := by
    rw [← hb]; exact lastFrom_reverse_initFrom a xs
  simp only [lastFrom_append, hlast, hb, lastFrom_cons, segCost_cons, h1]
  rw [hsym.1 y a]
  ring

/-- General case of `reverse_route_path`: on the cycle `a :: (xs ++ y :: ys)`, with `b` the
last vertex of `a :: xs`, the path `a .. b` is reversed in place. -/
theorem reverse_general_rep (ra : Bool) {fuel : Nat} {y : Int} {ys : List Int}
    (hsym : CostSym I) (hR : Rep I s A)
    (hA : A r = a :: (xs ++ y :: ys)) (hx : xs ≠ []) (hb : lastFrom a xs = b)
    (hf : xs.length < fuel) :
    ∃ s4, Solution.reverse_route_path I s ra r a b fuel = some s4 ∧
      Rep I s4 (upd A r ((a :: xs).reverse ++ y :: ys)) ∧
      s4.solution_cost = s.solution_cost +
        (cycCost I.cost ((a :: xs).reverse ++ y :: ys) - cycCost I.cost (A r)) ∧
      s4.do_list1 = (if ra then s.do_list1 ++ [Action.reverse_route_path r a b]
        else s.do_list1) ∧
      s4.undo_list1 = (if ra then s.undo_list1 ++ [Action.reverse_route_path r b a]
        else s.undo_list1) ∧
      s4.routes_pool = s.routes_pool ∧ s4.max_number_routes = s.max_number_routes := by
  obtain ⟨s2, hloop, hrev, hl1, hl2⟩ := reverse_loop_of_rep ra hR hA hx hb hf
  have rr := hR.routes r
  rw [hA] at rr
  have hcyc := rr.cycle (by simp)
  have hnd := rr.nodup
  have hseg := hcyc
  rw [IsCycle_cons, List.append_assoc, Seg_append, hb] at hseg
  obtain ⟨_, hs2⟩ := hseg
  simp only [List.cons_append, Seg_cons] at hs2
  obtain ⟨n1, _, _, hs3⟩ := hs2
  rw [Seg_append] at hs3
  simp only [Seg_cons, Seg_nil, and_true] at hs3
  obtain ⟨_, _, m2, _⟩ := hs3
  have hnd1 := List.nodup_cons.1 hnd
  have hbX : b ∈ a :: xs := hb ▸ lastFrom_mem a xs
  have hpY : lastFrom y ys ∈ y :: ys := lastFrom_mem y ys
  have hbpre : ¬ (b = s.get_prev_vertex r a ∧ a = s.get_next_vertex r b) := by
    rintro ⟨h1, _⟩
    rw [m2] at h1
    rcases List.mem_cons.1 hbX with e | e
    · exact hnd1.1 (e ▸ h1 ▸ List.mem_append_right _ hpY)
    · exact (List.disjoint_of_nodup_append hnd1.2) e (h1 ▸ hpY)
  have hres := Solution.reverse_route_path_general I s ra r a b fuel s2 hloop hbpre
  rw [m2, n1] at hres
  obtain ⟨g1, g2, g3, _, g5, g6⟩ := Solution.reverse_finish_scalars I s2 r a b (lastFrom y ys) y
  refine ⟨_, hres, reverse_general_finish_rep hsym hR hA hb hrev, ?_, ?_, ?_, ?_, ?_⟩
  · rw [g1, hrev.cost, hA, reverse_general_cost hsym hb]
  · rw [g5, hl1]; simp
  · rw [g6, hl2]; simp
  · rw [g2, hrev.pool]
  · rw [g3, hrev.maxr]

end ReverseRep2

section ReverseWhole

variable {I : Instance} {s : Solution} {A : Nat → List Int} {r : Nat} {a b : Int}
  {xs : List Int}

/-- The description of route `r` after the contiguous case of `reverse_route_path`: the
whole cycle is reversed. -/
theorem reverse_whole_routeRep {s2 : Solution} (hsym : CostSym I) (hR : Rep I s A)
    (hA : A r = a :: xs) (hb : lastFrom a xs = b)
    (hrev : Reversed s s2 r (a :: xs) b) :
    RouteRep I (Solution.reverse_finish_whole I s2 r a b (s.get_cost_prev_vertex r a)) r
      (a :: xs).reverse := by
  have rr := hR.routes r
  rw [hA] at rr
  have hcyc := rr.cycle (by simp)
  have hnd := rr.nodup
  obtain ⟨hs1, m1, m2, m3⟩ := IsCycle_last hcyc
  rw [hb] at m1 m2 m3
  have hbX : b ∈ a :: xs := hb ▸ lastFrom_mem a xs
  have enx := Solution.reverse_finish_whole_next I s2 r a b (s.get_cost_prev_vertex r a)
  have epv := Solution.reverse_finish_whole_prev I s2 r a b (s.get_cost_prev_vertex r a)
  have ecc := Solution.reverse_finish_whole_cc I s2 r a b (s.get_cost_prev_vertex r a)
  obtain ⟨f1, f2, f3⟩ := Solution.reverse_finish_whole_self I s2 r a b (s.get_cost_prev_vertex r a)
  have hlast : lastFrom b (initFrom a xs).reverse = a := by
    rw [← hb]; exact lastFrom_reverse_initFrom a xs
  have hR1 := Seg_reverse hsym.1 a xs hs1
  rw [hb] at hR1
  have hmem : ∀ u, u ∈ (a :: xs).reverse ↔ u ∈ a :: xs := fun u => List.mem_reverse
  exact
    { present_iff := by
        rw [f3, hrev.in_solution, ← rr.present_iff]; simp
      cycle := fun _ => by
        rw [reverse_cons_eq, hb, IsCycle_cons, Seg_append]
        refine ⟨Seg_frame b _ ?_ ?_ hR1, ?_⟩
        · intro u hu
          have hu1 : u ∈ b :: (initFrom a xs).reverse := initFrom_subset _ _ u hu
          have hu2 : u ∈ a :: xs := by
            rcases List.mem_cons.1 hu1 with e | e
            · exact e ▸ hbX
            · exact mem_initFrom_reverse a xs u e
          rw [enx, hrev.nx, if_pos hu2]
        · intro u hu
          have hu2 : u ∈ a :: xs := mem_initFrom_reverse a xs u hu
          have hub : u ≠ b := by
            intro e
            have := lastFrom_not_mem_initFrom a xs hnd
            rw [hb] at this
            subst e
            exact this (List.mem_reverse.1 hu)
          rw [epv, ecc, if_neg hub, hrev.pv, hrev.cc u hub, if_pos hu2, if_pos hu2]
          exact ⟨rfl, rfl⟩
        · rw [hlast]
          simp only [Seg_cons, Seg_nil, and_true]
          refine ⟨?_, ?_, ?_⟩
          · rw [enx, hrev.nx, if_pos (List.mem_cons_self _ _), m2]
          · rw [epv, hrev.pv, if_pos hbX, m1]
          · rw [ecc, if_pos rfl, m3]; exact hsym.1 b a
      nodup := List.nodup_reverse.2 hnd
      range := fun u hu => rr.range u ((hmem u).1 hu)
      mem_iff := fun u h0 => by
        rw [hmem, Solution.reverse_finish_whole_route_ptr, hrev.route_ptr]
        exact rr.mem_iff u h0
      load := fun _ => by
        rw [f1, hrev.load, rr.load (by simp)]
        exact loadOf_perm I (List.reverse_perm (a :: xs)).symm
      size := fun _ => by
        rw [f2, hrev.size, rr.size (by simp)]
        exact sizeOf_perm (List.reverse_perm (a :: xs)).symm
      missing := fun _ h0 => by
        have h0' : (0 : Int) ∉ a :: xs := fun h => h0 ((hmem 0).2 h)
        have hm := rr.missing (by simp) h0'
        have a1 := enx 0
        have a2 := epv 0
        rw [hrev.nx, if_neg h0', Solution.get_next_vertex_zero,
          Solution.get_next_vertex_zero] at a1
        rw [hrev.pv, if_neg h0', Solution.get_prev_vertex_zero,
          Solution.get_prev_vertex_zero] at a2
        rw [a1, a2]; exact hm }

/-- Contiguous case of `reverse_route_path` (`b` is the predecessor of `a`): the links of
the whole cycle are reversed consistently, and the stored cost is changed by
`-cost(b,a) - cost(b,a) + cost(b,b) + cost(a,a)`. -/
theorem reverse_whole_rep (ra : Bool) {fuel : Nat} (hsym : CostSym I) (hR : Rep I s A)
    (hA : A r = a :: xs) (hx : xs ≠ []) (hb : lastFrom a xs = b) (hf : xs.length < fuel) :
    ∃ s4, Solution.reverse_route_path I s ra r a b fuel = some s4 ∧
      Rep I s4 (upd A r (a :: xs).reverse) ∧
      s4.solution_cost = s.solution_cost +
        (- I.cost b a - I.cost b a + I.cost b b + I.cost a a) ∧
      s4.do_list1 = (if ra then s.do_list1 ++ [Action.reverse_route_path r a b]
        else s.do_list1) ∧
      s4.undo_list1 = (if ra then s.undo_list1 ++ [Action.reverse_route_path r b a]
        else s.undo_list1) ∧
      s4.routes_pool = s.routes_pool ∧ s4.max_number_routes = s.max_number_routes := by
  have hA2 : A r = a :: (xs ++ []) := by simpa using hA
  obtain ⟨s2, hloop, hrev, hl1, hl2⟩ := reverse_loop_of_rep ra hR hA2 hx hb hf
  have rr := hR.routes r
  rw [hA] at rr
  have hAr : A r ≠ [] := by rw [hA]; simp
  obtain ⟨_, m1, m2, _⟩ := IsCycle_last (rr.cycle (by simp))
  rw [hb] at m1 m2
  have hres := Solution.reverse_route_path_whole I s ra r a b fuel s2 hloop m2.symm m1.symm
  have hrr := reverse_whole_routeRep hsym hR hA hb hrev
  obtain ⟨g1, g2, g3, _, g5, g6⟩ :=
    Solution.reverse_finish_whole_scalars I s2 r a b (s.get_cost_prev_vertex r a)
  have hbX : b ∈ a :: xs := hb ▸ lastFrom_mem a xs
  have hmem : ∀ u, u ∈ (a :: xs).reverse ↔ u ∈ a :: xs := fun u => List.mem_reverse
  refine ⟨_, hres, ?_, ?_, ?_, ?_, by rw [g2, hrev.pool], by rw [g3, hrev.maxr]⟩
  · refine Rep_update hR hAr (by simp) (by rw [g2, hrev.pool]) (by rw [g3, hrev.maxr]) ?_ ?_ ?_ ?_
      hrr
    · intro r2 hr2
      have := Solution.reverse_finish_whole_routes_list I s2 r a b (s.get_cost_prev_vertex r a)
        r2 hr2
      rw [hrev.routes r2 hr2] at this
      exact this
    · intro u _ h1 _
      rw [hA] at h1
      have := Solution.reverse_finish_whole_customers_list I s2 r a b
        (s.get_cost_prev_vertex r a) u (fun e => h1 (e ▸ hbX))
      rw [hrev.custs u h1] at this
      exact this
    · intro u hu _ h1
      rw [hA] at h1
      exact absurd ((hmem u).1 hu) h1
    · intro u hu _ h1
      rw [hA] at hu
      exact absurd ((hmem u).2 hu) h1
  · rw [g1, hrev.cost]
  · rw [g5, hl1]; simp
  · rw [g6, hl2]; simp

theorem cycCost_reverse {cost : Int → Int → Int} (hsym : ∀ i j, cost i j = cost j i)
    (l : List Int) : cycCost cost l.reverse = cycCost cost l := by
  cases l with
  | nil => rfl
  | cons a xs =>
    rw [reverse_cons_eq, cycCost_eq, cycCost_eq, segCost_reverse hsym, lastFrom_reverse_initFrom]
    rw [hsym]

end ReverseWhole

/-! ## Walking a represented route -/

theorem length_le_of_range {l : List Int} {n : Nat} (hnd : l.Nodup)
    (hr : ∀ v ∈ l, 0 ≤ v ∧ v < (n : Int)) : l.length ≤ n := by
  have h1 : l.toFinset ⊆ Finset.Ico (0 : Int) n := by
    intro v hv
    rw [List.mem_toFinset] at hv
    rw [Finset.mem_Ico]
    exact hr v hv
  have h2 := Finset.card_le_card h1
  rw [List.toFinset_card_of_nodup hnd, Int.card_Ico] at h2
  simpa using h2

namespace Solution

theorem walk_of_chain (s : Solution) :
    ∀ (t : List Int) (x : Int) (fuel : Nat), t.length + 1 < fuel →
      NextChain (fun u => (s.customers_list u).next) x t 0 → (∀ u ∈ x :: t, u ≠ 0) →
      s.walk fuel x = some (x :: t) := by
  intro t
  induction t with
  | nil =>
    intro x fuel hf hc h0
    obtain ⟨f, rfl⟩ : ∃ f, fuel = f + 2 := ⟨fuel - 2, by simp at hf; omega⟩
    simp only [NextChain] at hc
    simp [walk, h0 x (by simp), hc]
  | cons y t ih =>
    intro x fuel hf hc h0
    obtain ⟨f, rfl⟩ : ∃ f, fuel = f + 1 := ⟨fuel - 1, by simp at hf; omega⟩
    simp only [NextChain] at hc
    have := ih y f (by simp at hf ⊢; omega) hc.2 (fun u hu => h0 u (List.mem_cons_of_mem _ hu))
    simp [walk, h0 x (by simp), hc.1, this]

theorem route_cost_loop_of_chain (I : Instance) (s : Solution) :
    ∀ (t : List Int) (x : Int) (fuel : Nat) (sum : Int), t.length + 1 < fuel →
      NextChain (fun u => (s.customers_list u).next) x t 0 → (∀ u ∈ x :: t, u ≠ 0) →
      route_cost_loop I s fuel x sum = some (sum + segCost I.cost x (t ++ [0])) := by
  intro t
  induction t with
  | nil =>
    intro x fuel sum hf hc h0
    obtain ⟨f, rfl⟩ : ∃ f, fuel = f + 2 := ⟨fuel - 2, by simp at hf; omega⟩
    simp only [NextChain] at hc
    simp [route_cost_loop, h0 x (by simp), hc]
  | cons y t ih =>
    intro x fuel sum hf hc h0
    obtain ⟨f, rfl⟩ : ∃ f, fuel = f + 1 := ⟨fuel - 1, by simp at hf; omega⟩
    simp only [NextChain] at hc
    have := ih y f (sum + I.cost x y) (by simp at hf ⊢; omega) hc.2
      (fun u hu => h0 u (List.mem_cons_of_mem _ hu))
    simp only [route_cost_loop, ne_eq, h0 x (by simp), not_false_eq_true, if_true, hc.1, this,
      List.cons_append, segCost_cons]
    congr 1
    ring

end Solution

section WalkRep

variable {I : Instance} {s : Solution} {r : Nat} {t : List Int}

theorem chain_of_routeRep (h : RouteRep I s r (0 :: t)) :
    (∀ u ∈ t, u ≠ 0) ∧
    (t = [] → (s.routes_list r).first_customer = 0) ∧
    (∀ x t2, t = x :: t2 → (s.routes_list r).first_customer = x ∧
      NextChain (fun u => (s.customers_list u).next) x t2 0) := by
  have hnd := h.nodup
  have h0 : ∀ u ∈ t, u ≠ 0 := by
    intro u hu e
    exact (List.nodup_cons.1 hnd).1 (e ▸ hu)
  have hcyc := h.cycle (by simp)
  refine ⟨h0, ?_, ?_⟩
  · rintro rfl
    rw [IsCycle_cons] at hcyc
    simp only [List.nil_append, Seg_cons] at hcyc
    rw [← Solution.get_next_vertex_zero]
    exact hcyc.1
  · rintro x t2 rfl
    obtain ⟨c1, _, _, c4, c5, _, _⟩ := IsCycle_head hcyc
    rw [Solution.get_next_vertex_zero] at c1
    refine ⟨c1, ?_⟩
    refine NextChain_congr x t2 0 (fun u hu => ?_) (NextChain_of_Seg x t2 0 c4 c5)
    exact (Solution.get_next_vertex_ne s r (h0 u hu)).symm

/-- Walking a represented route from `first_customer` to the depot visits exactly the
customers of its cycle, in order. -/
theorem route_customers_of_routeRep (h : RouteRep I s r (0 :: t)) {fuel : Nat}
    (hf : I.vertices_num < fuel) : s.route_customers r fuel = some t := by
  obtain ⟨h0, h1, h2⟩ := chain_of_routeRep h
  have hlen := length_le_of_range h.nodup h.range
  simp only [List.length_cons] at hlen
  unfold Solution.route_customers
  cases t with
  | nil =>
    rw [h1 rfl]
    obtain ⟨f, rfl⟩ : ∃ f, fuel = f + 1 := ⟨fuel - 1, by omega⟩
    simp [Solution.walk]
  | cons x t2 =>
    obtain ⟨e1, e2⟩ := h2 x t2 rfl
    rw [e1]
    simp only [List.length_cons] at hlen
    exact Solution.walk_of_chain s t2 x fuel (by omega) e2 h0

/-- The loop of `get_route_cost` on a represented route returns the arc cost of its cycle. -/
theorem get_route_cost_of_routeRep (h : RouteRep I s r (0 :: t)) {fuel : Nat}
    (hf : I.vertices_num < fuel) :
    Solution.get_route_cost I s r fuel = some (cycCost I.cost (0 :: t)) := by
  obtain ⟨h0, h1, h2⟩ := chain_of_routeRep h
  have hlen := length_le_of_range h.nodup h.range
  simp only [List.length_cons] at hlen
  unfold Solution.get_route_cost
  cases t with
  | nil =>
    simp only [h1 rfl]
    obtain ⟨f, rfl⟩ : ∃ f, fuel = f + 1 := ⟨fuel - 1, by omega⟩
    simp [Solution.route_cost_loop, cycCost]
  | cons x t2 =>
    obtain ⟨e1, e2⟩ := h2 x t2 rfl
    simp only [e1]
    simp only [List.length_cons] at hlen
    rw [Solution.route_cost_loop_of_chain I s t2 x fuel _ (by omega) e2 h0, cycCost_cons]
    simp

theorem loadOf_depot_cons (I : Instance) (h0 : ∀ u ∈ t, u ≠ 0) :
    loadOf I (0 :: t) = (t.map I.demand).sum ∧ sizeOf (0 :: t) = (t.length : Int) := by
  have : custs (0 :: t) = t := by
    unfold custs
    rw [List.filter_cons_of_neg (by simp)]
    exact List.filter_eq_self.2 (fun u hu => by simpa using h0 u hu)
  simp [loadOf, sizeOf, this]

/-- In a represented solution a present route that has its depot can be described by a
cycle starting at the depot. -/
theorem Rep.depot_first {A : Nat → List Int} (hR : Rep I s A) (hp : (s.routes_list r).in_solution = true)
    (hd : (s.routes_list r).first_customer ≠ -1) : ∃ t, A r ~r (0 :: t) := by
  have rr := hR.routes r
  have hne := rr.present_iff.2 hp
  have h0 : (0 : Int) ∈ A r := by
    by_contra h
    exact hd (rr.missing hne h).1
  exact exists_rotated_cons h0

end WalkRep

/-! ## The initial state -/

namespace Solution

theorem reset_routes_fields (s : Solution) (n : Nat) :
    (s.reset_routes n).customers_list = s.customers_list ∧
    (s.reset_routes n).solution_cost = s.solution_cost ∧
    (s.reset_routes n).max_number_routes = s.max_number_routes ∧
    (s.reset_routes n).routes_pool = s.routes_pool ∧
    (s.reset_routes n).cache = s.cache ∧
    (s.reset_routes n).depot_node = s.depot_node := by
  induction n with
  | zero => simp [reset_routes]
  | succ n ih => simpa [reset_routes, reset_route] using ih

theorem reset_routes_in_solution (s : Solution) (n : Nat) (r : Nat) :
    ((s.reset_routes n).routes_list r).in_solution =
      if r < n then false else (s.routes_list r).in_solution := by
  induction n with
  | zero => simp [reset_routes]
  | succ n ih =>
    simp only [reset_routes, reset_route]
    simp only [set_route_in_solution_r_in_solution, set_route_needs_cumulative_load_update_r_in_solution,
      set_route_next_r_in_solution, set_route_prev_r_in_solution, set_route_last_customer_r_in_solution,
      set_route_first_customer_r_in_solution, set_route_size_r_in_solution,
      set_route_load_r_in_solution, ih]
    split_ifs <;> first | rfl | omega

theorem reset_vertices_fields (s : Solution) (n : Nat) :
    (s.reset_vertices n).routes_list = s.routes_list ∧
    (s.reset_vertices n).solution_cost = s.solution_cost ∧
    (s.reset_vertices n).max_number_routes = s.max_number_routes ∧
    (s.reset_vertices n).routes_pool = s.routes_pool ∧
    (s.reset_vertices n).cache = s.cache ∧
    (s.reset_vertices n).depot_node = s.depot_node := by
  induction n with
  | zero => simp [reset_vertices]
  | succ n ih => simpa [reset_vertices, reset_vertex] using ih

theorem reset_vertices_customer (s : Solution) (n : Nat) (v : Int) :
    ((s.reset_vertices n).customers_list v).next =
      (if 0 ≤ v ∧ v < (n : Int) then -1 else (s.customers_list v).next) ∧
    ((s.reset_vertices n).customers_list v).prev =
      (if 0 ≤ v ∧ v < (n : Int) then -1 else (s.customers_list v).prev) ∧
    ((s.reset_vertices n).customers_list v).route_ptr =
      (if 0 ≤ v ∧ v < (n : Int) then 0 else (s.customers_list v).route_ptr) := by
  induction n with
  | zero =>
    have : ¬ (0 ≤ v ∧ v < ((0 : Nat) : Int)) := by
      intro h
      have := h.2
      simp at this
      omega
    simp only [reset_vertices, this, if_false]
    exact ⟨trivial, trivial, trivial⟩
  | succ n ih =>
    obtain ⟨i1, i2, i3⟩ := ih
    simp only [reset_vertices, reset_vertex]
    simp [i1, i2, i3]
    refine ⟨?_, ?_, ?_⟩ <;> split_ifs <;> first | rfl | omega

theorem reset_lists_cache (I : Instance) (h : Int) :
    (reset_lists I (construct I h)).cache.clear 1 = some (LRUCache.create h) := by
  unfold reset_lists
  rw [(reset_vertices_fields _ _).2.2.2.2.1, (reset_routes_fields _ _).2.2.2.2.1]
  rfl

theorem fresh_eq (I : Instance) (h : Int) :
    fresh I h = (reset_lists I (construct I h)).reset_finish (LRUCache.create h) := by
  unfold fresh reset
  simp only [reset_lists_cache]
  rfl

/-- On a freshly constructed solution `reset` returns with one unit of fuel: the cache is
empty, so its clearing loop stops at once. -/
theorem reset_construct (I : Instance) (h : Int) :
    reset I (construct I h) 1 = some (fresh I h) := by
  rw [fresh_eq]
  unfold reset
  simp only [reset_lists_cache]

theorem fresh_fields (I : Instance) (h : Int) :
    (fresh I h).solution_cost = 0 ∧
    (fresh I h).max_number_routes = I.vertices_num + 1 ∧
    (fresh I h).routes_pool.begin = 0 ∧
    (fresh I h).routes_pool.capacity = (I.vertices_num : Int) ∧
    (∀ i, 0 ≤ i → i < (I.vertices_num : Int) → (fresh I h).routes_pool.array i = (i + 1).toNat) ∧
    (fresh I h).cache = LRUCache.create h ∧
    (fresh I h).undo_list1 = [] ∧ (fresh I h).do_list1 = [] ∧
    (fresh I h).depot_node = ⟨0, 0⟩ := by
  rw [fresh_eq]
  refine ⟨?_, ?_, ?_, ?_, ?_, rfl, rfl, rfl, ?_⟩
  · show (Solution.reset_vertices _ _).solution_cost = 0
    rw [(reset_vertices_fields _ _).2.1, (reset_routes_fields _ _).2.1]
    rfl
  · show (reset_lists I (construct I h)).max_number_routes = _
    unfold reset_lists
    rw [(reset_vertices_fields _ _).2.2.1, (reset_routes_fields _ _).2.2.1]
    rfl
  · show (reset_lists I (construct I h)).routes_pool.begin = _
    unfold reset_lists
    rw [(reset_vertices_fields _ _).2.2.2.1, (reset_routes_fields _ _).2.2.2.1]
    rfl
  · show (reset_lists I (construct I h)).routes_pool.capacity = _
    unfold reset_lists
    rw [(reset_vertices_fields _ _).2.2.2.1, (reset_routes_fields _ _).2.2.2.1]
    rfl
  · intro i h1 h2
    show (reset_lists I (construct I h)).routes_pool.array i = _
    unfold reset_lists
    rw [(reset_vertices_fields _ _).2.2.2.1, (reset_routes_fields _ _).2.2.2.1]
    simp [reset_scalars, FixedSizeValueStack.reset, construct, h1, h2]
  · show (reset_lists I (construct I h)).depot_node = _
    unfold reset_lists
    rw [(reset_vertices_fields _ _).2.2.2.2.2, (reset_routes_fields _ _).2.2.2.2.2]
    rfl

theorem fresh_route (I : Instance) (h : Int) (r : Nat) :
    ((fresh I h).routes_list r).in_solution = false := by
  rw [fresh_eq]
  show ((reset_lists I (construct I h)).routes_list r).in_solution = false
  unfold reset_lists
  rw [(reset_vertices_fields _ _).1, reset_routes_in_solution]
  split_ifs <;> rfl

theorem fresh_customer (I : Instance) (h : Int) (v : Int) :
    ((fresh I h).customers_list v).route_ptr = 0 ∧
    (0 ≤ v → v < (I.vertices_num : Int) →
      ((fresh I h).customers_list v).next = -1 ∧ ((fresh I h).customers_list v).prev = -1) := by
  rw [fresh_eq]
  show ((reset_lists I (construct I h)).customers_list v).route_ptr = 0 ∧
    (0 ≤ v → v < (I.vertices_num : Int) →
      ((reset_lists I (construct I h)).customers_list v).next = -1 ∧
      ((reset_lists I (construct I h)).customers_list v).prev = -1)
  unfold reset_lists
  obtain ⟨i1, i2, i3⟩ := reset_vertices_customer
    ((construct I h).reset_scalars.reset_routes (construct I h).reset_scalars.max_number_routes)
    I.vertices_num v
  rw [i1, i2, i3]
  refine ⟨?_, fun h1 h2 => ?_⟩
  · split_ifs
    · rfl
    · rw [(reset_routes_fields _ _).1]
      rfl
  · simp [h1, h2]

end Solution

/-- The empty solution left by the constructor and `reset` is represented by the empty
family of routes. -/
theorem fresh_rep (I : Instance) (h : Int) : Rep I (Solution.fresh I h) (fun _ => []) := by
  obtain ⟨f1, f2, f3, f4, f5, _⟩ := Solution.fresh_fields I h
  refine ⟨fun r => ⟨?_, ?_, ?_, ?_, ?_, ?_, ?_, ?_⟩, ?_, ?_, ?_, ?_, ?_, ?_, ?_⟩
  · simp [Solution.fresh_route]
  · intro h; exact absurd rfl h
  · exact List.nodup_nil
  · intro v hv; exact absurd hv (List.not_mem_nil v)
  · intro v _
    simp only [List.not_mem_nil, false_iff, not_and, not_not]
    intro e
    rw [(Solution.fresh_customer I h v).1] at e
    exact e.symm
  · intro h; exact absurd rfl h
  · intro h; exact absurd rfl h
  · intro h; exact absurd rfl h
  · intro r h; exact absurd rfl h
  · intro v h1 h2 _
    exact (Solution.fresh_customer I h v).2 (le_of_lt h1) h2
  · rw [f3, f4]; exact Int.natCast_nonneg _
  · intro i h1 h2
    rw [f3] at h1
    rw [f4] at h2
    rw [f5 i h1 h2, f2]
    refine ⟨rfl, ?_, ?_⟩ <;> omega
  · intro i j h1 h2 h3 h4 e
    rw [f3] at h1 h3
    rw [f4] at h2 h4
    rw [f5 i h1 h2, f5 j h3 h4] at e
    omega
  · rw [f3]
  · rw [f4, f2]
    push_cast
    ring

theorem fresh_costOK (I : Instance) (h : Int) : CostOK I (Solution.fresh I h) (fun _ => []) := by
  unfold CostOK
  rw [(Solution.fresh_fields I h).1]
  simp [cycCost]

/-! ## The description of a solution determines its links -/

theorem upd_upd {α β : Type} [DecidableEq α] (f : α → β) (a : α) (b b2 : β) :
    upd (upd f a b) a b2 = upd f a b2 := by
  funext x
  simp only [upd]
  split_ifs <;> rfl

theorem upd_eq_self {α β : Type} [DecidableEq α] (f : α → β) (a : α) : upd f a (f a) = f := by
  funext x
  simp only [upd]
  split_ifs with h
  · rw [h]
  · rfl

theorem isRotated_ne_nil {l l2 : List Int} (hr : l ~r l2) : l ≠ [] ↔ l2 ≠ [] := by
  constructor
  · intro h2 h3; subst h3; exact h2 (List.isRotated_nil_iff.1 hr)
  · intro h2 h3; subst h3; exact h2 (List.isRotated_nil_iff'.1 hr).symm

/-- Rotating the descriptions of the routes keeps the invariant. -/
theorem Rep_of_rotated {I : Instance} {s : Solution} {A B : Nat → List Int} (hR : Rep I s A)
    (hr : ∀ r, A r ~r B r) : Rep I s B :=
  { routes := fun r => RouteRep_isRotated (hr r) (hR.routes r)
    bound := fun r h => hR.bound r ((isRotated_ne_nil (hr r)).2 h)
    unserved := hR.unserved
    pool_le := hR.pool_le
    pool_absent := fun i h1 h2 => by
      obtain ⟨a, b, c⟩ := hR.pool_absent i h1 h2
      refine ⟨?_, b, c⟩
      by_contra hl
      exact (isRotated_ne_nil (hr _)).2 hl a
    pool_inj := hR.pool_inj
    pool_nonneg := hR.pool_nonneg
    pool_cap := hR.pool_cap }

theorem CostOK_of_rotated {I : Instance} {s : Solution} {A B : Nat → List Int} (hC : CostOK I s A)
    (hr : ∀ r, A r ~r B r) : CostOK I s B := by
  unfold CostOK at hC ⊢
  rw [hC]
  exact Finset.sum_congr rfl (fun r _ => (cycCost_isRotated (hr r)).symm)

theorem isRotated_upd {A B : Nat → List Int} (hr : ∀ r, A r ~r B r) (r : Nat) {l l2 : List Int}
    (h : l ~r l2) : ∀ r2, upd A r l r2 ~r upd B r l2 r2 := by
  intro r2
  simp only [upd]
  split_ifs
  · exact h
  · exact hr r2

section Agree

variable {I : Instance} {s t : Solution} {A B : Nat → List Int}

theorem Rep.route_ptr_eq (h1 : Rep I s A) (h2 : Rep I t B) (hr : ∀ r, A r ~r B r) (u : Int)
    (hu : u ≠ 0) : (t.customers_list u).route_ptr = (s.customers_list u).route_ptr := by
  by_cases h : (s.customers_list u).route_ptr = 0
  · rw [h]
    by_contra h3
    have := ((h2.routes _).mem_iff u hu).2 ⟨rfl, h3⟩
    have := ((h1.routes _).mem_iff u hu).1 ((hr _).mem_iff.2 this)
    exact h3 (this.1 ▸ h)
  · have := ((h1.routes _).mem_iff u hu).2 ⟨rfl, h⟩
    exact (((h2.routes _).mem_iff u hu).1 ((hr _).mem_iff.1 this)).1

/-- Two solutions described by the same routes (up to rotation of the cyclic lists) have
the same links, route pointers, loads and sizes. -/
theorem Rep_agree (h1 : Rep I s A) (h2 : Rep I t B) (hr : ∀ r, A r ~r B r) : SameRoutes I s t := by
  have hptr := Rep.route_ptr_eq h1 h2 hr
  have hlinks : ∀ r, ∀ u ∈ A r, t.get_next_vertex r u = s.get_next_vertex r u ∧
      t.get_prev_vertex r u = s.get_prev_vertex r u := by
    intro r u hu
    have hne : A r ≠ [] := List.ne_nil_of_mem hu
    have c1 := (h1.routes r).cycle hne
    have c2 := (h2.routes r).cycle ((isRotated_ne_nil (hr r)).1 hne)
    have := IsCycle_unique (hr r) c1 c2 u hu
    exact ⟨this.1, this.2.1⟩
  have hcust : ∀ u, 0 < u → u < (I.vertices_num : Int) →
      (t.customers_list u).next = (s.customers_list u).next ∧
      (t.customers_list u).prev = (s.customers_list u).prev := by
    intro u hu1 hu2
    have hu : u ≠ 0 := ne_of_gt hu1
    by_cases h : (s.customers_list u).route_ptr = 0
    · have h3 : (t.customers_list u).route_ptr = 0 := by rw [hptr u hu, h]
      obtain ⟨a1, a2⟩ := h1.unserved u hu1 hu2 h
      obtain ⟨b1, b2⟩ := h2.unserved u hu1 hu2 h3
      rw [a1, a2, b1, b2]
      exact ⟨rfl, rfl⟩
    · have hm := ((h1.routes _).mem_iff u hu).2 ⟨rfl, h⟩
      have := hlinks _ u hm
      simpa [Solution.get_next_vertex, Solution.get_prev_vertex, hu] using this
  have hpres : ∀ r, (s.routes_list r).in_solution = true → A r ≠ [] := fun r h =>
    (h1.routes r).present_iff.2 h
  have hfl : ∀ r, (s.routes_list r).in_solution = true →
      (t.routes_list r).first_customer = (s.routes_list r).first_customer ∧
      (t.routes_list r).last_customer = (s.routes_list r).last_customer := by
    intro r h
    have hne := hpres r h
    by_cases h0 : (0 : Int) ∈ A r
    · have := hlinks r 0 h0
      simpa [Solution.get_next_vertex, Solution.get_prev_vertex] using this
    · obtain ⟨a1, a2⟩ := (h1.routes r).missing hne h0
      obtain ⟨b1, b2⟩ := (h2.routes r).missing ((isRotated_ne_nil (hr r)).1 hne)
        (fun h => h0 ((hr r).mem_iff.2 h))
      rw [a1, a2, b1, b2]
      exact ⟨rfl, rfl⟩
  exact
    { next := fun u a b => (hcust u a b).1
      prev := fun u a b => (hcust u a b).2
      route_ptr := fun u a _ => hptr u (ne_of_gt a)
      in_solution := fun r => by
        have a := (h1.routes r).present_iff
        have b := (h2.routes r).present_iff
        have c := isRotated_ne_nil (hr r)
        cases e1 : (s.routes_list r).in_solution <;> cases e2 : (t.routes_list r).in_solution
        · rfl
        · exact absurd (a.1 (c.2 (b.2 e2))) (by simp [e1])
        · exact absurd (b.1 (c.1 (a.2 e1))) (by simp [e2])
        · rfl
      first := fun r h => (hfl r h).1
      last := fun r h => (hfl r h).2
      load := fun r h => by
        have hne := hpres r h
        rw [(h1.routes r).load hne, (h2.routes r).load ((isRotated_ne_nil (hr r)).1 hne)]
        exact (loadOf_perm I (hr r).perm).symm
      size := fun r h => by
        have hne := hpres r h
        rw [(h1.routes r).size hne, (h2.routes r).size ((isRotated_ne_nil (hr r)).1 hne)]
        exact (sizeOf_perm (hr r).perm).symm }

/-- A vertex linked in route `r` belongs to the cycle describing `r`, and conversely. -/
theorem Rep.linked_iff (h1 : Rep I s A) (r : Nat) (v : Int) : s.linked r v ↔ v ∈ A r := by
  have rr := h1.routes r
  unfold Solution.linked
  constructor
  · rintro ⟨hp, h⟩
    have hne := rr.present_iff.2 hp
    by_cases hv : v = 0
    · subst hv
      simp only [if_true] at h
      by_contra h0
      exact h (rr.missing hne h0).1
    · simp only [hv, if_false] at h
      exact (rr.mem_iff v hv).2 ⟨h, Nat.pos_iff_ne_zero.1 (h1.bound r hne).1⟩
  · intro hm
    have hne : A r ≠ [] := List.ne_nil_of_mem hm
    refine ⟨rr.present_iff.1 hne, ?_⟩
    by_cases hv : v = 0
    · subst hv
      simp only [if_true]
      have hc := rr.cycle hne
      have := (IsCycle_facts hc 0 hm).2.2.1
      rw [Solution.get_next_vertex_zero] at this
      intro e
      rw [e] at this
      have := (rr.range _ this).1
      omega
    · simp only [hv, if_false]
      exact ((rr.mem_iff v hv).1 hm).1

/-- In a represented solution the links of every linked vertex are mutually inverse, and
the cached cost of a linked vertex is the cost of the arc entering it. -/
theorem Rep.links (h1 : Rep I s A) (r : Nat) (v : Int) (hl : s.linked r v) :
    s.get_prev_vertex r (s.get_next_vertex r v) = v ∧
    s.get_next_vertex r (s.get_prev_vertex r v) = v ∧
    s.get_cost_prev_vertex r v = I.cost (s.get_prev_vertex r v) v := by
  have hm := (h1.linked_iff r v).1 hl
  have hc := (h1.routes r).cycle (List.ne_nil_of_mem hm)
  have := IsCycle_facts hc v hm
  exact ⟨this.1, this.2.1, this.2.2.2.2⟩

end Agree

/-! ## The operations on routes given up to rotation -/

section Ops

variable {I : Instance} {s : Solution} {A : Nat → List Int} {r : Nat}

theorem remove_vertex_ok (ra : Bool) (hR : Rep I s A) {v : Int} {t : List Int}
    (hA : A r ~r (v :: t)) (ht : t ≠ []) :
    Rep I (Solution.remove_vertex I s ra r v).1 (upd A r t) ∧
    (Solution.remove_vertex I s ra r v).1.solution_cost =
      s.solution_cost + (cycCost I.cost t - cycCost I.cost (v :: t)) := by
  have hR2 := Rep_isRotated hR hA
  have h1 := remove_vertex_rep ra hR2 (upd_same A r (v :: t)) ht
  have h2 := remove_vertex_cost_eq ra hR2 (upd_same A r (v :: t)) ht
  rw [upd_upd] at h1
  rw [upd_same] at h2
  exact ⟨h1, h2⟩

theorem insert_vertex_ok (ra : Bool) (hR : Rep I s A) {w v : Int} {t : List Int}
    (hA : A r ~r (w :: t)) (hv : v ∉ A r) (hv1 : v ≠ 0 → (s.customers_list v).route_ptr = 0)
    (hrange : 0 ≤ v ∧ v < (I.vertices_num : Int)) :
    Rep I (Solution.insert_vertex_before I s ra r w v) (upd A r (v :: w :: t)) ∧
    (Solution.insert_vertex_before I s ra r w v).solution_cost =
      s.solution_cost + (cycCost I.cost (v :: w :: t) - cycCost I.cost (w :: t)) := by
  have hR2 := Rep_isRotated hR hA
  have hv2 : v ∉ upd A r (w :: t) r := by
    rw [upd_same]
    exact fun h => hv (hA.mem_iff.2 h)
  have h1 := insert_vertex_rep ra hR2 (upd_same A r (w :: t)) hv2 hv1 hrange
  have h2 := insert_vertex_cost_eq ra hR2 (upd_same A r (w :: t)) hv2
  rw [upd_upd] at h1
  rw [upd_same] at h2
  exact ⟨h1, h2⟩

theorem remove_route_ok (ra : Bool) (hR : Rep I s A) (hA : A r = [0]) :
    Rep I (s.remove_route ra r) (upd A r []) := remove_route_rep ra hR hA

/-- The path from `a` to `b` inside a cycle containing both. -/
theorem exists_path_of_mem {l : List Int} {a b : Int} (ha : a ∈ l) (hb : b ∈ l) (hab : a ≠ b) :
    ∃ xs ys, l ~r (a :: (xs ++ ys)) ∧ xs ≠ [] ∧ lastFrom a xs = b := by
  obtain ⟨t, ht⟩ := exists_rotated_cons ha
  have hb2 : b ∈ t := by
    have := ht.mem_iff.1 hb
    simp only [List.mem_cons] at this
    exact this.resolve_left (fun e => hab e.symm)
  obtain ⟨p, q, rfl⟩ := List.append_of_mem hb2
  refine ⟨p ++ [b], q, by simpa using ht, by simp, by simp⟩

theorem prev_of_rep (hR : Rep I s A) {a : Int} {l : List Int} (hA : A r ~r (a :: l)) :
    s.get_prev_vertex r a = lastFrom a l ∧ s.get_next_vertex r (lastFrom a l) = a := by
  have hne : A r ≠ [] := (isRotated_ne_nil hA).2 (by simp)
  have hc := IsCycle_isRotated hA ((hR.routes r).cycle hne)
  cases l with
  | nil =>
    rw [IsCycle_cons] at hc
    simp only [List.nil_append, Seg_cons] at hc
    exact ⟨hc.2.1, hc.1⟩
  | cons y t =>
    obtain ⟨_, _, _, _, c5, c6, _⟩ := IsCycle_head hc
    exact ⟨c6, c5⟩

/-- Reversal of the path `a .. b` of route `r`, in both cases of the source: the path is
followed by other vertices of the cycle (`ys ≠ []`) or it is the whole cycle. -/
theorem reverse_ok (ra : Bool) {fuel : Nat} (hsym : CostSym I) (hR : Rep I s A) {a b : Int}
    {xs ys : List Int} (hA : A r ~r (a :: (xs ++ ys))) (hx : xs ≠ []) (hb : lastFrom a xs = b)
    (hf : xs.length < fuel) :
    ∃ s4, Solution.reverse_route_path I s ra r a b fuel = some s4 ∧
      Rep I s4 (upd A r ((a :: xs).reverse ++ ys)) ∧
      s4.solution_cost = s.solution_cost +
        (if ys = [] then - 2 * I.cost b a
         else cycCost I.cost ((a :: xs).reverse ++ ys) - cycCost I.cost (a :: (xs ++ ys))) ∧
      s4.do_list1 = (if ra then s.do_list1 ++ [Action.reverse_route_path r a b]
        else s.do_list1) ∧
      s4.undo_list1 = (if ra then s.undo_list1 ++ [Action.reverse_route_path r b a]
        else s.undo_list1) ∧
      s4.routes_pool = s.routes_pool ∧ s4.max_number_routes = s.max_number_routes := by
  have hR2 := Rep_isRotated hR hA
  cases ys with
  | nil =>
    simp only [List.append_nil] at hA hR2 ⊢
    obtain ⟨s4, e, h1, h2, h3, h4, h5, h6⟩ :=
      reverse_whole_rep ra hsym hR2 (upd_same A r (a :: xs)) hx hb hf
    rw [upd_upd] at h1
    refine ⟨s4, e, h1, ?_, h3, h4, h5, h6⟩
    rw [h2, hsym.2 b, hsym.2 a]
    simp only [if_true]
    ring
  | cons y ys =>
    obtain ⟨s4, e, h1, h2, h3, h4, h5, h6⟩ :=
      reverse_general_rep ra hsym hR2 (upd_same A r (a :: (xs ++ y :: ys))) hx hb hf
    rw [upd_upd] at h1
    rw [upd_same] at h2
    refine ⟨s4, e, h1, ?_, h3, h4, h5, h6⟩
    rw [h2]; simp

end Ops

/-! ## Consequences of the representation read on the state -/

section Consequences

variable {I : Instance} {s : Solution} {A : Nat → List Int}

theorem Rep.linksOK (hR : Rep I s A) : s.LinksOK := fun r v hl =>
  ⟨(hR.links r v hl).1, (hR.links r v hl).2.1⟩

theorem Rep.cachedOK (hR : Rep I s A) : s.CachedOK I := fun r v hl => (hR.links r v hl).2.2

theorem Rep.loadOK (hR : Rep I s A) : s.LoadOK I := by
  intro r hp hd
  obtain ⟨t, ht⟩ := hR.depot_first hp hd
  have rr := RouteRep_isRotated ht (hR.routes r)
  obtain ⟨h0, _, _⟩ := chain_of_routeRep rr
  obtain ⟨e1, e2⟩ := loadOf_depot_cons I h0
  refine ⟨t, route_customers_of_routeRep rr (Nat.lt_succ_self _), ?_, ?_⟩
  · rw [rr.load (by simp), e1]
  · rw [rr.size (by simp), e2]

theorem Rep.routeCostsOK (hR : Rep I s A) : s.RouteCostsOK I A := by
  intro r hp hd
  obtain ⟨t, ht⟩ := hR.depot_first hp hd
  have rr := RouteRep_isRotated ht (hR.routes r)
  rw [get_route_cost_of_routeRep rr (Nat.lt_succ_self _), cycCost_isRotated ht]

theorem Rep.route_ptr_zero (hR : Rep I s A) {v : Int} (hv : v ≠ 0) (h : ∀ r, v ∉ A r) :
    (s.customers_list v).route_ptr = 0 := by
  by_contra h2
  exact h _ (((hR.routes _).mem_iff v hv).2 ⟨rfl, h2⟩)

theorem Rep.length_le (hR : Rep I s A) (r : Nat) : (A r).length ≤ I.vertices_num :=
  length_le_of_range (hR.routes r).nodup (hR.routes r).range

theorem exists_rotated_of_mem_ne {l : List Int} {v : Int} (hv : v ∈ l) (h : ∃ u ∈ l, u ≠ v) :
    ∃ t, l ~r (v :: t) ∧ t ≠ [] := by
  obtain ⟨t, ht⟩ := exists_rotated_cons hv
  refine ⟨t, ht, ?_⟩
  rintro rfl
  obtain ⟨u, hu, hne⟩ := h
  have := ht.mem_iff.1 hu
  simp only [List.mem_singleton] at this
  exact hne this

/-- A vertex whose successor is another vertex is followed by it in the cycle. -/
theorem exists_rotated_next (hR : Rep I s A) {r : Nat} {v : Int} (hv : v ∈ A r)
    (hw : s.get_next_vertex r v ≠ v) : ∃ t, A r ~r (v :: s.get_next_vertex r v :: t) := by
  obtain ⟨t, ht⟩ := exists_rotated_cons hv
  have hc := IsCycle_isRotated ht ((hR.routes r).cycle (List.ne_nil_of_mem hv))
  cases t with
  | nil =>
    rw [IsCycle_cons] at hc
    simp only [List.nil_append, Seg_cons] at hc
    exact absurd hc.1 hw
  | cons y t =>
    obtain ⟨c1, _⟩ := IsCycle_head hc
    rw [c1]
    exact ⟨t, ht⟩

end Consequences

/-! ## Effect of `append_route` -/

namespace Solution

section Append

variable (I : Instance) (s : Solution) (R S : Nat)

theorem append_route_eq (fuel : Nat) :
    append_route I s R S fuel =
      (append_loop R fuel (s.append_link I R S) (s.routes_list S).first_customer).map
        (fun s8 => (s8.remove_route false S).set_route_needs_cumulative_load_update R true) := by
  unfold append_route
  cases h : append_loop R fuel (s.append_link I R S) (s.routes_list S).first_customer with
  | none =>
    have h2 : append_loop R fuel (s.append_link I R S) (s.routes_list S).first_customer = none := h
    unfold append_link at h2
    simp only [h2, Option.map_none']
  | some s8 =>
    have h2 : append_loop R fuel (s.append_link I R S) (s.routes_list S).first_customer
      = some s8 := h
    unfold append_link at h2
    simp only [h2, Option.map_some']
    rfl

theorem append_link_customer (u : Int) :
    ((s.append_link I R S).customers_list u).next =
      (if u = (s.routes_list R).last_customer then (s.routes_list S).first_customer
       else (s.customers_list u).next) ∧
    ((s.append_link I R S).customers_list u).prev =
      (if u = (s.routes_list S).first_customer then (s.routes_list R).last_customer
       else (s.customers_list u).prev) ∧
    ((s.append_link I R S).customers_list u).c_prev_curr =
      (if u = (s.routes_list S).first_customer then
        I.cost (s.routes_list R).last_customer (s.routes_list S).first_customer
       else (s.customers_list u).c_prev_curr) ∧
    ((s.append_link I R S).customers_list u).route_ptr = (s.customers_list u).route_ptr := by
  simp [append_link]

theorem append_link_route (hRS : R ≠ S) :
    ((s.append_link I R S).routes_list R).first_customer = (s.routes_list R).first_customer ∧
    ((s.append_link I R S).routes_list R).last_customer = (s.routes_list S).last_customer ∧
    ((s.append_link I R S).routes_list R).load = (s.routes_list R).load + (s.routes_list S).load ∧
    ((s.append_link I R S).routes_list R).size = (s.routes_list R).size + (s.routes_list S).size ∧
    ((s.append_link I R S).routes_list R).c_prev_curr = (s.routes_list S).c_prev_curr ∧
    ((s.append_link I R S).routes_list R).in_solution = (s.routes_list R).in_solution := by
  have h : S ≠ R := fun e => hRS e.symm
  simp [append_link, h]

theorem append_link_routes_list (q : Nat) (hq : q ≠ R) :
    RouteNode.agree ((s.append_link I R S).routes_list q) (s.routes_list q) := by
  unfold RouteNode.agree
  simp [append_link, hq]

theorem append_link_scalars :
    (s.append_link I R S).solution_cost = s.solution_cost +
      (I.cost (s.routes_list R).last_customer (s.routes_list S).first_customer
        - I.cost (s.routes_list R).last_customer 0 - I.cost 0 (s.routes_list S).first_customer) ∧
    (s.append_link I R S).routes_pool = s.routes_pool ∧
    (s.append_link I R S).max_number_routes = s.max_number_routes ∧
    (s.append_link I R S).do_list1 = s.do_list1 ∧
    (s.append_link I R S).undo_list1 = s.undo_list1 := by
  simp [append_link]

end Append

/-- The loop of `append_route` started at `x`, when following `next` from `x` runs through
`l` and reaches the depot: the vertices of `x :: l` get the route pointer `R`, nothing else
changes but the cache. -/
theorem append_loop_spec (R : Nat) :
    ∀ (l : List Int) (x : Int) (fuel : Nat) (s : Solution), l.length + 1 < fuel →
      NextChain (fun u => (s.customers_list u).next) x l 0 → (∀ u ∈ x :: l, u ≠ 0) →
      ∃ s8, append_loop R fuel s x = some s8 ∧
        (∀ u, (s8.customers_list u).next = (s.customers_list u).next ∧
          (s8.customers_list u).prev = (s.customers_list u).prev ∧
          (s8.customers_list u).c_prev_curr = (s.customers_list u).c_prev_curr ∧
          (s8.customers_list u).route_ptr =
            if u ∈ x :: l then R else (s.customers_list u).route_ptr) ∧
        s8.routes_list = s.routes_list ∧ s8.solution_cost = s.solution_cost ∧
        s8.routes_pool = s.routes_pool ∧ s8.max_number_routes = s.max_number_routes ∧
        s8.depot_node = s.depot_node ∧
        s8.do_list1 = s.do_list1 ∧ s8.undo_list1 = s.undo_list1 := by
  intro l
  induction l with
  | nil =>
    intro x fuel s hf hc h0
    obtain ⟨f, rfl⟩ : ∃ f, fuel = f + 2 := ⟨fuel - 2, by simp at hf; omega⟩
    simp only [NextChain] at hc
    have hx : x ≠ 0 := h0 x (by simp)
    refine ⟨(s.set_customer_route_ptr x R).cache_insert x, ?_, ?_, rfl, rfl, rfl, rfl, rfl, rfl, rfl⟩
    · simp [append_loop, hx, hc]
    · intro u
      simp
  | cons y t ih =>
    intro x fuel s hf hc h0
    obtain ⟨f, rfl⟩ : ∃ f, fuel = f + 1 := ⟨fuel - 1, by simp at hf; omega⟩
    simp only [NextChain] at hc
    have hx : x ≠ 0 := h0 x (by simp)
    have hc2 : NextChain (fun u => (((s.set_customer_route_ptr x R).cache_insert x
        ).customers_list u).next) y t 0 := by
      refine NextChain_congr y t 0 (fun u _ => ?_) hc.2
      simp
    obtain ⟨s8, e, k1, k2, k3, k4, k5, k6, k7, k8⟩ :=
      ih y f ((s.set_customer_route_ptr x R).cache_insert x) (by simp at hf ⊢; omega) hc2
        (fun u hu => h0 u (List.mem_cons_of_mem _ hu))
    refine ⟨s8, ?_, ?_, k2, k3, k4, k5, k6, k7, k8⟩
    · simp only [append_loop, ne_eq, hx, not_false_eq_true, if_true]
      simp only [cache_insert_customers_list, set_customer_route_ptr_c_next, hc.1]
      exact e
    · intro u
      obtain ⟨j1, j2, j3, j4⟩ := k1 u
      refine ⟨by rw [j1]; simp, by rw [j2]; simp, by rw [j3]; simp, ?_⟩
      rw [j4]
      simp only [cache_insert_customers_list, set_customer_route_ptr_c_route_ptr, List.mem_cons]
      by_cases h1 : u = x
      · simp [h1]
      · simp [h1]

end Solution

section AppendRep

variable {I : Instance} {s : Solution} {A : Nat → List Int} {R S : Nat} {LR LS : List Int}

theorem last_of_routeRep {r : Nat} {t : List Int} (h : RouteRep I s r (0 :: t)) :
    (s.routes_list r).last_customer = lastFrom 0 t := by
  have hc := h.cycle (by simp)
  rw [← Solution.get_prev_vertex_zero]
  cases t with
  | nil =>
    rw [IsCycle_cons] at hc
    simp only [List.nil_append, Seg_cons] at hc
    exact hc.2.1
  | cons y t =>
    obtain ⟨_, _, _, _, _, c6, _⟩ := IsCycle_head hc
    exact c6

/-- The fields of the state returned by `append_route`, when route `R` is the cycle
`0 :: LR` and route `S` the cycle `0 :: LS`, both with customers. -/
theorem append_route_fields (hR : Rep I s A) (hRS : R ≠ S) (hAR : A R = 0 :: LR)
    (hAS : A S = 0 :: LS) (hLS : LS ≠ []) {fuel : Nat} (hf : LS.length < fuel) :
    ∃ s9, Solution.append_route I s R S fuel = some s9 ∧
      (∀ u, (s9.customers_list u).next =
          (if u = lastFrom 0 LR then LS.head! else (s.customers_list u).next) ∧
        (s9.customers_list u).prev =
          (if u = LS.head! then lastFrom 0 LR else (s.customers_list u).prev) ∧
        (s9.customers_list u).c_prev_curr =
          (if u = LS.head! then I.cost (lastFrom 0 LR) LS.head!
           else (s.customers_list u).c_prev_curr) ∧
        (s9.customers_list u).route_ptr =
          (if u ∈ LS then R else (s.customers_list u).route_ptr)) ∧
      ((s9.routes_list R).first_customer = (s.routes_list R).first_customer ∧
        (s9.routes_list R).last_customer = (s.routes_list S).last_customer ∧
        (s9.routes_list R).load = (s.routes_list R).load + (s.routes_list S).load ∧
        (s9.routes_list R).size = (s.routes_list R).size + (s.routes_list S).size ∧
        (s9.routes_list R).c_prev_curr = (s.routes_list S).c_prev_curr ∧
        (s9.routes_list R).in_solution = (s.routes_list R).in_solution) ∧
      (∀ q, q ≠ R → q ≠ S → RouteNode.agree (s9.routes_list q) (s.routes_list q)) ∧
      (s9.routes_list S).in_solution = false ∧
      s9.solution_cost = s.solution_cost +
        (I.cost (lastFrom 0 LR) LS.head! - I.cost (lastFrom 0 LR) 0 - I.cost 0 LS.head!) ∧
      s9.routes_pool = s.routes_pool.push S ∧
      s9.max_number_routes = s.max_number_routes ∧
      s9.do_list1 = s.do_list1 ∧ s9.undo_list1 = s.undo_list1 := by
  have rR := hR.routes R
  have rS := hR.routes S
  rw [hAR] at rR
  rw [hAS] at rS
  have he := last_of_routeRep rR
  obtain ⟨h0, _, hch⟩ := chain_of_routeRep rS
  obtain ⟨x, t2, rfl⟩ : ∃ x t2, LS = x :: t2 := by
    cases LS with
    | nil => exact absurd rfl hLS
    | cons x t2 => exact ⟨x, t2, rfl⟩
  obtain ⟨hst, hchain⟩ := hch x t2 rfl
  have hhead : (x :: t2).head! = x := rfl
  rw [hhead]
  -- the last customer of `R` is not a customer of `S`
  have heS : ∀ u ∈ x :: t2, u ≠ lastFrom 0 LR := by
    intro u hu e
    have hu0 := h0 u hu
    have h1 : u ∈ A S := by rw [hAS]; exact List.mem_cons_of_mem _ hu
    have h2 : u ∈ A R := by rw [hAR, e]; exact lastFrom_mem 0 LR
    exact hR.not_mem_of_ne hRS hu0 h1 h2
  have hch7 : NextChain (fun u => ((s.append_link I R S).customers_list u).next) x t2 0 := by
    refine NextChain_congr x t2 0 (fun u hu => ?_) hchain
    rw [(Solution.append_link_customer I s R S u).1, he, if_neg (heS u hu)]
  obtain ⟨s8, e8, k1, k2, k3, k4, k5, _, k7, k8⟩ :=
    Solution.append_loop_spec R t2 x fuel (s.append_link I R S) (by simpa using hf) hch7 h0
  obtain ⟨m1, m2, m3, m4, m5⟩ := Solution.append_link_scalars I s R S
  have hres : Solution.append_route I s R S fuel =
      some ((s8.remove_route false S).set_route_needs_cumulative_load_update R true) := by
    rw [Solution.append_route_eq, hst, e8]
    rfl
  have hcl := Solution.remove_route_customers_list s8 false S
  obtain ⟨e1, e2, e3, _, _⟩ := Solution.remove_route_scalars s8 false S
  obtain ⟨l1, l2⟩ := Solution.remove_route_lists s8 false S
  refine ⟨_, hres, ?_, ?_, ?_, ?_, ?_, ?_, ?_, ?_, ?_⟩
  · intro u
    obtain ⟨j1, j2, j3, j4⟩ := k1 u
    obtain ⟨a1, a2, a3, a4⟩ := Solution.append_link_customer I s R S u
    simp only [Solution.set_route_needs_cumulative_load_update_customers_list, hcl]
    rw [j1, j2, j3, j4, a1, a2, a3, a4, he, hst]
    exact ⟨rfl, rfl, rfl, rfl⟩
  · obtain ⟨a1, a2, a3, a4, a5, a6⟩ := Solution.append_link_route I s R S hRS
    obtain ⟨b1, b2, b3, b4, b5, b6⟩ := Solution.remove_route_routes_list s8 false S R hRS
    rw [k2] at b1 b2 b3 b4 b5 b6
    simp only [Solution.set_route_needs_cumulative_load_update_r_first_customer,
      Solution.set_route_needs_cumulative_load_update_r_last_customer,
      Solution.set_route_needs_cumulative_load_update_r_load,
      Solution.set_route_needs_cumulative_load_update_r_size,
      Solution.set_route_needs_cumulative_load_update_r_c_prev_curr,
      Solution.set_route_needs_cumulative_load_update_r_in_solution]
    rw [b1, b2, b3, b4, b5, b6, a1, a2, a3, a4, a5, a6]
    exact ⟨rfl, rfl, rfl, rfl, rfl, rfl⟩
  · intro q hq1 hq2
    obtain ⟨a1, a2, a3, a4, a5, a6⟩ := Solution.append_link_routes_list I s R S q hq1
    obtain ⟨b1, b2, b3, b4, b5, b6⟩ := Solution.remove_route_routes_list s8 false S q hq2
    rw [k2] at b1 b2 b3 b4 b5 b6
    unfold RouteNode.agree
    simp only [Solution.set_route_needs_cumulative_load_update_r_first_customer,
      Solution.set_route_needs_cumulative_load_update_r_last_customer,
      Solution.set_route_needs_cumulative_load_update_r_load,
      Solution.set_route_needs_cumulative_load_update_r_size,
      Solution.set_route_needs_cumulative_load_update_r_c_prev_curr,
      Solution.set_route_needs_cumulative_load_update_r_in_solution]
    rw [b1, b2, b3, b4, b5, b6, a1, a2, a3, a4, a5, a6]
    exact ⟨rfl, rfl, rfl, rfl, rfl, rfl⟩
  · simp only [Solution.set_route_needs_cumulative_load_update_r_in_solution]
    exact (Solution.remove_route_self s8 false S).1
  · simp only [Solution.set_route_needs_cumulative_load_update_solution_cost]
    rw [e1, k3, m1, he, hst]
  · simp only [Solution.set_route_needs_cumulative_load_update_routes_pool]
    rw [e3, k4, m2]
  · simp only [Solution.set_route_needs_cumulative_load_update_max_number_routes]
    rw [e2, k5, m3]
  · simp only [Solution.set_route_needs_cumulative_load_update_do_list1]
    rw [l1, k7, m4]; rfl
  · simp only [Solution.set_route_needs_cumulative_load_update_undo_list1]
    rw [l2, k8, m5]; rfl

end AppendRep

section AppendRep2

variable {I : Instance} {s : Solution} {A : Nat → List Int} {R S : Nat} {LR LS : List Int}

/-- The description of route `R` after `append_route(R, S)`: the customers of `S` follow
those of `R`. -/
theorem append_route_routeRep {s9 : Solution} (hR : Rep I s A) (hRS : R ≠ S)
    (hAR : A R = 0 :: LR) (hAS : A S = 0 :: LS) (hLR : LR ≠ []) (hLS : LS ≠ [])
    (hcust : ∀ u, (s9.customers_list u).next =
          (if u = lastFrom 0 LR then LS.head! else (s.customers_list u).next) ∧
        (s9.customers_list u).prev =
          (if u = LS.head! then lastFrom 0 LR else (s.customers_list u).prev) ∧
        (s9.customers_list u).c_prev_curr =
          (if u = LS.head! then I.cost (lastFrom 0 LR) LS.head!
           else (s.customers_list u).c_prev_curr) ∧
        (s9.customers_list u).route_ptr =
          (if u ∈ LS then R else (s.customers_list u).route_ptr))
    (hroute : (s9.routes_list R).first_customer = (s.routes_list R).first_customer ∧
        (s9.routes_list R).last_customer = (s.routes_list S).last_customer ∧
        (s9.routes_list R).load = (s.routes_list R).load + (s.routes_list S).load ∧
        (s9.routes_list R).size = (s.routes_list R).size + (s.routes_list S).size ∧
        (s9.routes_list R).c_prev_curr = (s.routes_list S).c_prev_curr ∧
        (s9.routes_list R).in_solution = (s.routes_list R).in_solution) :
    RouteRep I s9 R (0 :: (LR ++ LS)) := by
  have rR := hR.routes R
  have rS := hR.routes S
  rw [hAR] at rR
  rw [hAS] at rS
  obtain ⟨x, t2, rfl⟩ : ∃ x t2, LS = x :: t2 := by
    cases LS with
    | nil => exact absurd rfl hLS
    | cons x t2 => exact ⟨x, t2, rfl⟩
  have hhead : (x :: t2).head! = x := rfl
  rw [hhead] at hcust
  obtain ⟨q1, q2, q3, q4, q5, q6⟩ := hroute
  have ndR := rR.nodup
  have ndS := rS.nodup
  have h0R : ∀ u ∈ LR, u ≠ 0 := fun u hu e => (List.nodup_cons.1 ndR).1 (e ▸ hu)
  have h0S : ∀ u ∈ x :: t2, u ≠ 0 := fun u hu e => (List.nodup_cons.1 ndS).1 (e ▸ hu)
  have hdis : ∀ u ∈ LR, u ∉ x :: t2 := by
    intro u hu hu2
    have h1 : u ∈ A R := by rw [hAR]; exact List.mem_cons_of_mem _ hu
    have h2 : u ∈ A S := by rw [hAS]; exact List.mem_cons_of_mem _ hu2
    exact hR.not_mem_of_ne hRS (h0R u hu) h2 h1
  have heLR : lastFrom 0 LR ∈ LR := lastFrom_mem_of_ne_nil 0 LR hLR
  have he0 : lastFrom 0 LR ≠ 0 := h0R _ heLR
  have hx0 : x ≠ 0 := h0S x (by simp)
  have hxLR : x ∉ LR := fun h => hdis x h (by simp)
  have heS : lastFrom 0 LR ∉ x :: t2 := hdis _ heLR
  have hR0 : R ≠ 0 := Nat.pos_iff_ne_zero.1 (hR.bound R (by rw [hAR]; simp)).1
  have cR := rR.cycle (by simp)
  have cS := rS.cycle (by simp)
  rw [IsCycle_cons, Seg_append] at cR
  rw [IsCycle_cons] at cS
  simp only [List.cons_append, Seg_cons] at cS
  obtain ⟨_, _, _, cS4⟩ := cS
  refine
    { present_iff := by
        rw [q6]
        simpa using rR.present_iff.1 (by simp)
      cycle := fun _ => ?_
      nodup := ?_
      range := ?_
      mem_iff := ?_
      load := fun _ => ?_
      size := fun _ => ?_
      missing := fun _ h => absurd (List.mem_cons_self _ _) h }
  · rw [IsCycle_cons, List.append_assoc, Seg_append]
    refine ⟨Seg_frame 0 LR ?_ ?_ cR.1, ?_⟩
    · intro u hu
      have hne : u ≠ lastFrom 0 LR := fun e => lastFrom_not_mem_initFrom 0 LR ndR (e ▸ hu)
      by_cases hu0 : u = 0
      · subst hu0
        simp [Solution.get_next_vertex, q1]
      · simp [Solution.get_next_vertex, hu0, (hcust u).1, hne]
    · intro u hu
      have hu0 := h0R u hu
      have hux : u ≠ x := fun e => hxLR (e ▸ hu)
      simp [Solution.get_prev_vertex, Solution.get_cost_prev_vertex, hu0, (hcust u).2.1,
        (hcust u).2.2.1, hux]
    · simp only [List.cons_append, Seg_cons]
      refine ⟨?_, ?_, ?_, Seg_frame x (t2 ++ [0]) ?_ ?_ cS4⟩
      · simp [Solution.get_next_vertex, he0, (hcust _).1]
      · simp [Solution.get_prev_vertex, hx0, (hcust x).2.1]
      · simp [Solution.get_cost_prev_vertex, hx0, (hcust x).2.2.1]
      · intro u hu
        rw [initFrom_append_singleton] at hu
        have hu0 := h0S u hu
        have hne : u ≠ lastFrom 0 LR := fun e => heS (e ▸ hu)
        simp [Solution.get_next_vertex, hu0, (hcust u).1, hne]
      · intro u hu
        rcases List.mem_append.1 hu with h | h
        · have hu0 := h0S u (List.mem_cons_of_mem _ h)
          have hux : u ≠ x := fun e => (List.nodup_cons.1 (List.nodup_cons.1 ndS).2).1 (e ▸ h)
          simp [Solution.get_prev_vertex, Solution.get_cost_prev_vertex, hu0, (hcust u).2.1,
            (hcust u).2.2.1, hux]
        · simp only [List.mem_singleton] at h
          subst h
          simp [Solution.get_prev_vertex, Solution.get_cost_prev_vertex, q2, q5]
  · refine List.nodup_cons.2 ⟨?_, List.nodup_append.2 ⟨(List.nodup_cons.1 ndR).2,
      (List.nodup_cons.1 ndS).2, fun u hu hu2 => hdis u hu hu2⟩⟩
    intro h
    rcases List.mem_append.1 h with h | h
    · exact h0R 0 h rfl
    · exact h0S 0 h rfl
  · intro v hv
    rcases List.mem_cons.1 hv with h | h
    · exact rR.range v (h ▸ List.mem_cons_self _ _)
    · rcases List.mem_append.1 h with h | h
      · exact rR.range v (List.mem_cons_of_mem _ h)
      · exact rS.range v (List.mem_cons_of_mem _ h)
  · intro v hv0
    rw [(hcust v).2.2.2]
    by_cases hvS : v ∈ x :: t2
    · simp only [hvS, if_true, true_and]
      constructor
      · intro _; exact hR0
      · intro _
        exact List.mem_cons_of_mem _ (List.mem_append_right _ hvS)
    · simp only [hvS, if_false]
      rw [← rR.mem_iff v hv0]
      simp only [List.mem_cons, List.mem_append] at hvS ⊢
      tauto
  · rw [q3, rR.load (by simp), rS.load (by simp)]
    simp only [loadOf_cons, loadOf_append, if_true]
    ring
  · rw [q4, rR.size (by simp), rS.size (by simp)]
    simp only [sizeOf_cons, sizeOf_append, if_true]
    ring

end AppendRep2

section AppendRep3

variable {I : Instance} {s : Solution} {A : Nat → List Int} {R S : Nat} {LR LS : List Int}

theorem append_cost_eq (cost : Int → Int → Int) (LR : List Int) (x : Int) (t2 : List Int) :
    cycCost cost (0 :: (LR ++ x :: t2)) - cycCost cost (0 :: LR) - cycCost cost (0 :: x :: t2) =
      cost (lastFrom 0 LR) x - cost (lastFrom 0 LR) 0 - cost 0 x := by
  simp only [cycCost_cons, List.append_assoc, List.cons_append, segCost_append, segCost_cons,
    segCost_nil, lastFrom_cons]
  ring

/-- Abstract effect of `append_route(R, S)`: route `S` leaves the solution and its customers
follow those of `R`. -/
theorem append_route_rep (hR : Rep I s A) (hRS : R ≠ S) (hAR : A R = 0 :: LR)
    (hAS : A S = 0 :: LS) (hLR : LR ≠ []) (hLS : LS ≠ []) {fuel : Nat} (hf : LS.length < fuel) :
    ∃ s9, Solution.append_route I s R S fuel = some s9 ∧
      Rep I s9 (upd (upd A S []) R (0 :: (LR ++ LS))) ∧
      s9.solution_cost = s.solution_cost +
        (cycCost I.cost (0 :: (LR ++ LS)) - cycCost I.cost (0 :: LR) - cycCost I.cost (0 :: LS)) ∧
      s9.max_number_routes = s.max_number_routes := by
  obtain ⟨s9, e9, hcust, hroute, hother, hS, hcost, hpool, hmax, _, _⟩ :=
    append_route_fields hR hRS hAR hAS hLS hf
  have hrr := append_route_routeRep hR hRS hAR hAS hLR hLS hcust hroute
  have rR := hR.routes R
  have rS := hR.routes S
  rw [hAR] at rR
  rw [hAS] at rS
  have hARne : A R ≠ [] := by rw [hAR]; simp
  have hASne : A S ≠ [] := by rw [hAS]; simp
  have hR0 : R ≠ 0 := Nat.pos_iff_ne_zero.1 (hR.bound R hARne).1
  have hS0 : S ≠ 0 := Nat.pos_iff_ne_zero.1 (hR.bound S hASne).1
  obtain ⟨hb1, hb2⟩ := hR.bound S hASne
  have h0S : ∀ u ∈ LS, u ≠ 0 := fun u hu e => (List.nodup_cons.1 rS.nodup).1 (e ▸ hu)
  have hheadS : LS.head! ∈ LS := by
    cases LS with
    | nil => exact absurd rfl hLS
    | cons x t2 => exact List.mem_cons_self _ _
  have heLR : lastFrom 0 LR ∈ LR := lastFrom_mem_of_ne_nil 0 LR hLR
  have h0R : ∀ u ∈ LR, u ≠ 0 := fun u hu e => (List.nodup_cons.1 rR.nodup).1 (e ▸ hu)
  have hptrS : ∀ u ∈ LS, (s.customers_list u).route_ptr = S := fun u hu =>
    ((rS.mem_iff u (h0S u hu)).1 (List.mem_cons_of_mem _ hu)).1
  have hptrR : ∀ u ∈ LR, (s.customers_list u).route_ptr = R := fun u hu =>
    ((rR.mem_iff u (h0R u hu)).1 (List.mem_cons_of_mem _ hu)).1
  -- customers outside both routes keep their node
  have hkeep : ∀ u, (s.customers_list u).route_ptr ≠ R → (s.customers_list u).route_ptr ≠ S →
      CustomerNode.agree (s9.customers_list u) (s.customers_list u) := by
    intro u h1 h2
    have hS2 : u ∉ LS := fun h => h2 (hptrS u h)
    have hx : u ≠ LS.head! := fun e => hS2 (e ▸ hheadS)
    have he : u ≠ lastFrom 0 LR := fun e => h1 (e ▸ hptrR _ heLR)
    obtain ⟨a1, a2, a3, a4⟩ := hcust u
    unfold CustomerNode.agree
    rw [a1, a2, a3, a4]
    simp [hS2, hx, he]
  have hpa : ∀ i, s.routes_pool.begin ≤ i → i < s.routes_pool.capacity →
      s.routes_pool.array i ≠ S ∧ s.routes_pool.array i ≠ R := by
    intro i h1 h2
    have := (hR.pool_absent i h1 h2).1
    exact ⟨fun h => hASne (h ▸ this), fun h => hARne (h ▸ this)⟩
  have key : ∀ q, upd (upd A S []) R (0 :: (LR ++ LS)) q ≠ [] → A q ≠ [] := by
    intro q h
    by_cases e : q = R
    · subst e; exact hARne
    · rw [upd_other _ _ _ _ e] at h
      by_cases e2 : q = S
      · subst e2; exact hASne
      · rwa [upd_other _ _ _ _ e2] at h
  refine ⟨s9, e9, ?_, ?_, hmax⟩
  · exact
      { routes := fun q => by
          by_cases e : q = R
          · subst e; rw [upd_same]; exact hrr
          · rw [upd_other _ _ _ _ e]
            by_cases e2 : q = S
            · subst e2
              rw [upd_same]
              exact
                { present_iff := by simp [hS]
                  cycle := fun h => absurd rfl h
                  nodup := List.nodup_nil
                  range := fun u hu => absurd hu (List.not_mem_nil u)
                  mem_iff := fun u h0 => by
                    simp only [List.not_mem_nil, false_iff, not_and, not_not]
                    intro hp
                    rw [(hcust u).2.2.2] at hp
                    by_cases hu : u ∈ LS
                    · rw [if_pos hu] at hp
                      exact absurd hp hRS
                    · rw [if_neg hu] at hp
                      by_contra hq0
                      have := (rS.mem_iff u h0).2 ⟨hp, hq0⟩
                      simp only [List.mem_cons] at this
                      exact hu (this.resolve_left h0)
                  load := fun h => absurd rfl h
                  size := fun h => absurd rfl h
                  missing := fun h => absurd rfl h }
            · rw [upd_other _ _ _ _ e2]
              refine RouteRep_frame (hR.routes q) (hother q e e2) ?_ ?_
              · intro u hu h0
                have hp := ((hR.routes q).mem_iff u h0).1 hu
                exact hkeep u (fun h => e (hp.1.symm.trans h)) (fun h => e2 (hp.1.symm.trans h))
              · intro u h0 hu hp
                rw [(hcust u).2.2.2] at hp
                by_cases hu2 : u ∈ LS
                · rw [if_pos hu2] at hp
                  exact absurd hp.symm e
                · rw [if_neg hu2] at hp
                  by_contra hq0
                  exact hu (((hR.routes q).mem_iff u h0).2 ⟨hp, hq0⟩)
        bound := fun q h => by rw [hmax]; exact hR.bound q (key q h)
        unserved := fun v h1 h2 h3 => by
          rw [(hcust v).2.2.2] at h3
          by_cases hv : v ∈ LS
          · rw [if_pos hv] at h3
            exact absurd h3 hR0
          · rw [if_neg hv] at h3
            obtain ⟨a1, a2, _, _⟩ := hkeep v (fun h => hR0 (h ▸ h3)) (fun h => hS0 (h ▸ h3))
            rw [a1, a2]
            exact hR.unserved v h1 h2 h3
        pool_le := by
          rw [hpool]
          have := hR.pool_le
          simp only [FixedSizeValueStack.push]
          omega
        pool_absent := fun i h1 h2 => by
          rw [hpool] at h1 h2 ⊢
          rw [hmax]
          simp only [FixedSizeValueStack.push] at h1 h2 ⊢
          by_cases e : i = s.routes_pool.begin - 1
          · rw [e, upd_same, upd_other _ _ _ _ (fun h => hRS h.symm), upd_same]
            exact ⟨rfl, hb1, hb2⟩
          · rw [upd_other _ _ _ _ e]
            obtain ⟨a, b, c⟩ := hR.pool_absent i (by omega) h2
            obtain ⟨p1, p2⟩ := hpa i (by omega) h2
            refine ⟨?_, b, c⟩
            rw [upd_other _ _ _ _ p2, upd_other _ _ _ _ p1]
            exact a
        pool_inj := fun i j h1 h2 h3 h4 h5 => by
          rw [hpool] at h1 h2 h3 h4 h5
          simp only [FixedSizeValueStack.push] at h1 h2 h3 h4 h5
          by_cases ei : i = s.routes_pool.begin - 1 <;> by_cases ej : j = s.routes_pool.begin - 1
          · omega
          · rw [ei, upd_same, upd_other _ _ _ _ ej] at h5
            exact absurd h5.symm (hpa j (by omega) h4).1
          · rw [ej, upd_same, upd_other _ _ _ _ ei] at h5
            exact absurd h5 (hpa i (by omega) h2).1
          · rw [upd_other _ _ _ _ ei, upd_other _ _ _ _ ej] at h5
            exact hR.pool_inj i j (by omega) h2 (by omega) h4 h5
        pool_nonneg := by
          rw [hpool]
          have := hR.pool_begin_pos hASne
          simp only [FixedSizeValueStack.push]
          omega
        pool_cap := by
          rw [hpool, hmax]
          simp only [FixedSizeValueStack.push]
          exact hR.pool_cap }
  · rw [hcost]
    cases LS with
    | nil => exact absurd rfl hLS
    | cons x t2 =>
      rw [append_cost_eq I.cost LR x t2]
      rfl

theorem append_route_costOK (hR : Rep I s A) (hC : CostOK I s A) (hRS : R ≠ S)
    (hAR : A R = 0 :: LR) (hAS : A S = 0 :: LS) {s9 : Solution}
    (hcost : s9.solution_cost = s.solution_cost +
        (cycCost I.cost (0 :: (LR ++ LS)) - cycCost I.cost (0 :: LR) - cycCost I.cost (0 :: LS)))
    (hmax : s9.max_number_routes = s.max_number_routes) :
    CostOK I s9 (upd (upd A S []) R (0 :: (LR ++ LS))) := by
  have hbR := (hR.bound R (by rw [hAR]; simp)).2
  have hbS := (hR.bound S (by rw [hAS]; simp)).2
  unfold CostOK at hC ⊢
  rw [hmax, sum_upd _ (cycCost I.cost) _ R _ hbR, sum_upd A (cycCost I.cost) _ S _ hbS, hcost, hC,
    upd_other _ _ _ _ hRS, hAR, hAS]
  simp only [cycCost]
  ring

end AppendRep3

section AppendRotated

variable {I : Instance} {s : Solution} {A : Nat → List Int} {R S : Nat}

/-- The operation `append_route(R, S)` on two distinct routes that have their depot and
customers. -/
theorem append_route_ok (hR : Rep I s A) (hRS : R ≠ S) (h0R : (0 : Int) ∈ A R)
    (h0S : (0 : Int) ∈ A S) (hcR : ∃ u ∈ A R, u ≠ 0) (hcS : ∃ u ∈ A S, u ≠ 0) {fuel : Nat}
    (hf : I.vertices_num ≤ fuel) :
    ∃ s9 LR LS, Solution.append_route I s R S fuel = some s9 ∧
      A R ~r (0 :: LR) ∧ A S ~r (0 :: LS) ∧
      Rep I s9 (upd (upd A S []) R (0 :: (LR ++ LS))) ∧
      s9.solution_cost = s.solution_cost +
        (cycCost I.cost (0 :: (LR ++ LS)) - cycCost I.cost (0 :: LR) - cycCost I.cost (0 :: LS)) ∧
      s9.max_number_routes = s.max_number_routes := by
  obtain ⟨LR, hLR, hne1⟩ := exists_rotated_of_mem_ne h0R hcR
  obtain ⟨LS, hLS, hne2⟩ := exists_rotated_of_mem_ne h0S hcS
  have hR1 := Rep_isRotated hR hLR
  have hLS2 : upd A R (0 :: LR) S ~r (0 :: LS) := by
    rw [upd_other _ _ _ _ (fun h => hRS h.symm)]; exact hLS
  have hR2 := Rep_isRotated hR1 hLS2
  have hlen : LS.length < fuel := by
    have h1 := hR.length_le S
    have h2 := hLS.perm.length_eq
    simp only [List.length_cons] at h2
    omega
  obtain ⟨s9, e, h1, h2, h3⟩ := append_route_rep hR2 hRS
    (by rw [upd_other _ _ _ _ hRS, upd_same]) (upd_same _ S _) hne1 hne2 hlen
  refine ⟨s9, LR, LS, e, hLR, hLS, ?_, h2, h3⟩
  have : upd (upd (upd (upd A R (0 :: LR)) S (0 :: LS)) S []) R (0 :: (LR ++ LS)) =
      upd (upd A S []) R (0 :: (LR ++ LS)) := by
    funext q
    simp only [upd]
    split_ifs <;> rfl
  rw [this] at h1
  exact h1

end AppendRotated

/-! ## Replaying the undo list: one recorded action at a time -/

section UndoSteps

variable {I : Instance} {t : Solution} {B : Nat → List Int} {r : Nat}

theorem CostOK_update_rot {s s2 : Solution} {A : Nat → List Int} {l l2 : List Int}
    (hR : Rep I s A) (hC : CostOK I s A) (hA : A r ~r l) (hl : l ≠ [])
    (hmax : s2.max_number_routes = s.max_number_routes)
    (hcost : s2.solution_cost = s.solution_cost + (cycCost I.cost l2 - cycCost I.cost l)) :
    CostOK I s2 (upd A r l2) := by
  refine CostOK_update hC (hR.bound r ((isRotated_ne_nil hA).2 hl)).2 hmax ?_
  rw [hcost, cycCost_isRotated hA]

theorem remove_vertex_ok2 (ra : Bool) (hR : Rep I t B) (hC : CostOK I t B) {v : Int}
    {l : List Int} (hA : B r ~r (v :: l)) (hl : l ≠ []) :
    Rep I (Solution.remove_vertex I t ra r v).1 (upd B r l) ∧
    CostOK I (Solution.remove_vertex I t ra r v).1 (upd B r l) ∧
    (Solution.remove_vertex I t ra r v).1.routes_pool = t.routes_pool ∧
    (Solution.remove_vertex I t ra r v).1.max_number_routes = t.max_number_routes := by
  obtain ⟨h1, h2⟩ := remove_vertex_ok ra hR hA hl
  obtain ⟨p1, p2, _⟩ := Solution.remove_vertex_pool I t ra r v
  exact ⟨h1, CostOK_update_rot hR hC hA (by simp) p2 h2, p1, p2⟩

theorem insert_vertex_ok2 (ra : Bool) (hR : Rep I t B) (hC : CostOK I t B) {w v : Int}
    {l : List Int} (hA : B r ~r (w :: l)) (hv : v ∉ B r)
    (hv1 : v ≠ 0 → (t.customers_list v).route_ptr = 0)
    (hrange : 0 ≤ v ∧ v < (I.vertices_num : Int)) :
    Rep I (Solution.insert_vertex_before I t ra r w v) (upd B r (v :: w :: l)) ∧
    CostOK I (Solution.insert_vertex_before I t ra r w v) (upd B r (v :: w :: l)) ∧
    (Solution.insert_vertex_before I t ra r w v).routes_pool = t.routes_pool ∧
    (Solution.insert_vertex_before I t ra r w v).max_number_routes = t.max_number_routes := by
  obtain ⟨h1, h2⟩ := insert_vertex_ok ra hR hA hv hv1 hrange
  obtain ⟨p1, p2, _⟩ := Solution.insert_vertex_pool I t ra r w v
  exact ⟨h1, CostOK_update_rot hR hC hA (by simp) p2 h2, p1, p2⟩

/-- Replaying `INSERT_VERTEX(r, w, v)` on a state where route `r` is present. -/
theorem undo_remove (fuel : Nat) (hR : Rep I t B) (hC : CostOK I t B) {w v : Int} {l : List Int}
    (hA : B r ~r (w :: l)) (hv : v ∉ B r) (hv1 : v ≠ 0 → (t.customers_list v).route_ptr = 0)
    (hrange : 0 ≤ v ∧ v < (I.vertices_num : Int)) :
    ∃ t2, Solution.apply_action I t (Action.insert_vertex r w v) fuel = some t2 ∧
      Rep I t2 (upd B r (v :: w :: l)) ∧ CostOK I t2 (upd B r (v :: w :: l)) ∧
      t2.routes_pool = t.routes_pool ∧ t2.max_number_routes = t.max_number_routes := by
  have hp : t.is_route_in_solution r = true :=
    (hR.routes r).present_iff.1 ((isRotated_ne_nil hA).2 (by simp))
  refine ⟨Solution.insert_vertex_before I t false r w v, ?_, insert_vertex_ok2 false hR hC hA hv hv1 hrange⟩
  simp [Solution.apply_action, Action.insert_vertex, hp]

/-- Replaying `REMOVE_VERTEX(r, v)`. -/
theorem undo_insert (fuel : Nat) (hR : Rep I t B) (hC : CostOK I t B) {v : Int} {l : List Int}
    (hA : B r ~r (v :: l)) (hl : l ≠ []) :
    ∃ t2, Solution.apply_action I t (Action.remove_vertex r v) fuel = some t2 ∧
      Rep I t2 (upd B r l) ∧ CostOK I t2 (upd B r l) ∧
      t2.routes_pool = t.routes_pool ∧ t2.max_number_routes = t.max_number_routes :=
  ⟨(Solution.remove_vertex I t false r v).1, by simp [Solution.apply_action, Action.remove_vertex],
    remove_vertex_ok2 false hR hC hA hl⟩

/-- Replaying `REMOVE_ONE_CUSTOMER_ROUTE(r, c)` on the route `depot, c, depot`. -/
theorem undo_build (fuel : Nat) (hsym : CostSym I) (hR : Rep I t B) (hC : CostOK I t B) {c : Int}
    (hA : B r ~r [0, c]) :
    ∃ t2, Solution.apply_action I t (Action.remove_one_customer_route r c) fuel = some t2 ∧
      Rep I t2 (upd B r []) ∧ CostOK I t2 (upd B r []) ∧
      t2.routes_pool = t.routes_pool.push r ∧ t2.max_number_routes = t.max_number_routes := by
  have hA2 : B r ~r (c :: [0]) := hA.trans ⟨1, rfl⟩
  obtain ⟨h1, h2, h3, h4⟩ := remove_vertex_ok2 false hR hC hA2 (by simp)
  have h5 := remove_route_rep false h1 (upd_same B r [0])
  have h6 := remove_route_costOK false hsym h1 h2 (upd_same B r [0])
  rw [upd_upd] at h5 h6
  obtain ⟨_, e2, e3, _⟩ := Solution.remove_route_scalars (Solution.remove_vertex I t false r c).1 false r
  refine ⟨(Solution.remove_vertex I t false r c).1.remove_route false r, ?_, h5, h6, ?_, ?_⟩
  · simp [Solution.apply_action, Action.remove_one_customer_route]
  · rw [e3, h3]
  · rw [e2, h4]

/-- Replaying `INSERT_VERTEX(r, depot, c)` on a state where route `r` is absent and on top
of the pool: the route is built again under the same index. -/
theorem undo_empty (fuel : Nat) (hsym : CostSym I) (hR : Rep I t B) (hC : CostOK I t B) {c : Int}
    (hB : B r = []) (hc : 0 < c ∧ c < (I.vertices_num : Int))
    (hun : (t.customers_list c).route_ptr = 0)
    (hpool : t.routes_pool.begin < t.routes_pool.capacity)
    (htop : t.routes_pool.array t.routes_pool.begin = r) :
    ∃ t2, Solution.apply_action I t (Action.insert_vertex r 0 c) fuel = some t2 ∧
      Rep I t2 (upd B r [0, c]) ∧ CostOK I t2 (upd B r [0, c]) ∧
      t2.routes_pool = t.routes_pool.get.2 ∧ t2.max_number_routes = t.max_number_routes := by
  have hp : t.is_route_in_solution r = false := by
    unfold Solution.is_route_in_solution
    cases e : (t.routes_list r).in_solution
    · rfl
    · exact absurd hB ((hR.routes r).present_iff.2 e)
  have h1 := build_rep false hsym hR hc hun hpool
  have h2 := build_costOK false (c := c) hsym hR hC hpool
  rw [Solution.build_route_eq, htop] at h1 h2
  obtain ⟨_, e2, e3, e4, e5, _⟩ := Solution.build_scalars I t false c
  refine ⟨(Solution.build_one_customer_route I t false c).2, ?_, h1, h2, ?_, e2⟩
  · simp [Solution.apply_action, Action.insert_vertex, hp]
  · cases hq : (Solution.build_one_customer_route I t false c).2.routes_pool with
    | mk arr bg cp =>
      rw [hq] at e3 e4 e5
      simp only at e3 e4 e5
      subst e3 e4 e5
      rfl

/-- Replaying `REVERSE_ROUTE_PATH(r, b, a)` on the cycle in which the path `a .. b` has
been reversed and is followed by other vertices. -/
theorem undo_reverse {fuel : Nat} (hsym : CostSym I) (hR : Rep I t B) (hC : CostOK I t B)
    {a b y : Int} {xs ys : List Int} (hA : B r ~r ((a :: xs).reverse ++ y :: ys)) (hx : xs ≠ [])
    (hb : lastFrom a xs = b) (hf : xs.length < fuel) :
    ∃ t2, Solution.apply_action I t (Action.reverse_route_path r b a) fuel = some t2 ∧
      Rep I t2 (upd B r (a :: (xs ++ y :: ys))) ∧ CostOK I t2 (upd B r (a :: (xs ++ y :: ys))) ∧
      t2.routes_pool = t.routes_pool ∧ t2.max_number_routes = t.max_number_routes := by
  have e1 : (a :: xs).reverse = b :: (initFrom a xs).reverse := by rw [reverse_cons_eq, hb]
  have hA2 : B r ~r (b :: ((initFrom a xs).reverse ++ y :: ys)) := by
    rw [e1] at hA; exact hA
  have hx2 : (initFrom a xs).reverse ≠ [] := by
    cases xs with
    | nil => exact absurd rfl hx
    | cons z zs => simp
  have hl2 : lastFrom b (initFrom a xs).reverse = a := by
    rw [← hb]; exact lastFrom_reverse_initFrom a xs
  have hlen : ((initFrom a xs).reverse).length < fuel := by
    have : (initFrom a xs).length = xs.length := by
      have := congrArg List.length (initFrom_append_lastFrom a xs)
      simp only [List.length_append, List.length_cons, List.length_nil] at this
      omega
    rw [List.length_reverse, this]; exact hf
  obtain ⟨t2, e, h1, h2, _, _, h5, h6⟩ := reverse_ok false hsym hR hA2 hx2 hl2 hlen
  have e2 : (b :: (initFrom a xs).reverse).reverse ++ y :: ys = a :: (xs ++ y :: ys) := by
    rw [← e1, List.reverse_reverse]; rfl
  rw [e2] at h1 h2
  refine ⟨t2, ?_, h1, ?_, h5, h6⟩
  · simpa [Solution.apply_action, Action.reverse_route_path] using e
  · refine CostOK_update_rot hR hC hA2 (by simp) h6 ?_
    rw [h2]
    simp

end UndoSteps

/-! ## Replaying the undo list of a recorded trajectory -/

section RelLemmas

variable {p : Option Nat} {A C B : Nat → List Int} {ps pt : FixedSizeValueStack} {r : Nat}

theorem PoolEq.refl (q : FixedSizeValueStack) : PoolEq q q := ⟨rfl, rfl, fun _ _ _ => rfl⟩

theorem Rel.route (h : Rel p A B ps pt) (hp : p ≠ some r) : A r ~r B r := by
  cases p with
  | none => exact h.1 r
  | some r2 => exact h.2.2.1 r (fun e => hp (by rw [e]))

theorem Rel.pending (h : Rel (some r) A B ps pt) : A r = [0] ∧ B r = [] := ⟨h.1, h.2.1⟩

/-- A customer that is in no cycle of `A` but possibly that of `r` is in no cycle of `B`
but possibly that of `r`. -/
theorem Rel.not_mem (h : Rel p A B ps pt) {v : Int} (hv : ∀ q, q ≠ r → v ∉ A q) :
    ∀ q, q ≠ r → v ∉ B q := by
  intro q hq hm
  cases p with
  | none => exact hv q hq ((h.1 q).mem_iff.2 hm)
  | some r2 =>
    by_cases e : q = r2
    · subst e
      rw [h.2.1] at hm
      exact absurd hm (List.not_mem_nil v)
    · exact hv q hq ((h.2.2.1 q e).mem_iff.2 hm)

/-- The relation is kept when one route, not the pending one, is updated on both sides. -/
theorem Rel.update (h : Rel p (upd A r (C r)) B ps pt) (hp : p ≠ some r) {l : List Int}
    (hl : A r ~r l) : Rel p A (upd B r l) ps pt := by
  cases p with
  | none =>
    refine ⟨fun q => ?_, h.2⟩
    by_cases e : q = r
    · subst e; rw [upd_same]; exact hl
    · have := h.1 q
      rwa [upd_other _ _ _ _ e, ← upd_other B r l q e] at this
  | some r2 =>
    have hne : r2 ≠ r := fun e => hp (by rw [e])
    obtain ⟨h1, h2, h3, h4⟩ := h
    rw [upd_other _ _ _ _ hne] at h1
    refine ⟨h1, by rw [upd_other _ _ _ _ hne]; exact h2, fun q hq => ?_, h4⟩
    by_cases e : q = r
    · subst e; rw [upd_same]; exact hl
    · have := h3 q hq
      rwa [upd_other _ _ _ _ e, ← upd_other B r l q e] at this

end RelLemmas

section Rewind

variable {I : Instance} {fuel : Nat} {s0 s : Solution} {A0 A : Nat → List Int} {p : Option Nat}

theorem apply_actions_snoc (l : List Action) (u : Action) (t : Solution) :
    Solution.apply_actions I fuel (l ++ [u]).reverse t =
      (Solution.apply_action I t u fuel).bind (Solution.apply_actions I fuel l.reverse) := by
  rw [List.reverse_append, List.reverse_singleton, List.singleton_append]
  simp only [Solution.apply_actions]
  cases Solution.apply_action I t u fuel <;> rfl

theorem Rewinds_start (hR : Rep I s0 A0) (hC : CostOK I s0 A0) (h0 : s0.undo_list1 = []) :
    Rewinds I fuel s0 A0 none s0 A0 := by
  refine ⟨hR, hC, (fun r h => by cases h), fun t B hB hCB hm hrel => ?_⟩
  rw [h0]
  exact ⟨t, B, rfl, hB, hCB, hrel.1, hm, hrel.2⟩

/-- A customer of route `r` is in no other cycle; the depot is not concerned. -/
theorem Rep.not_mem_others (hR : Rep I s A) {r : Nat} {v : Int} (hv : v ∈ A r) (hv0 : v ≠ 0) :
    ∀ q, q ≠ r → v ∉ A q := fun _ hq => hR.not_mem_of_ne hq hv0 hv

theorem Rep.route_ptr_zero2 {t : Solution} {B : Nat → List Int} (hB : Rep I t B) {r : Nat}
    {v : Int} (h1 : v ∉ B r) (h2 : ∀ q, q ≠ r → v ∉ B q) (hv0 : v ≠ 0) :
    (t.customers_list v).route_ptr = 0 := by
  refine hB.route_ptr_zero hv0 (fun q => ?_)
  by_cases e : q = r
  · subst e; exact h1
  · exact h2 q e

theorem Rewinds_remove (hw : Rewinds I fuel s0 A0 p s A) {r : Nat} {v : Int}
    (hl : s.linked r v) (hn : s.get_next_vertex r v ≠ v) (hp : p ≠ some r) :
    ∃ A2, Rewinds I fuel s0 A0 p (Solution.remove_vertex I s true r v).1 A2 := by
  obtain ⟨hR, hC, hpend, hback⟩ := hw
  have hv := (hR.linked_iff r v).1 hl
  obtain ⟨l, hrot⟩ := exists_rotated_next hR hv hn
  obtain ⟨f1, f2, f3, f4⟩ := remove_vertex_ok2 true hR hC hrot (by simp)
  have hnd : (v :: s.get_next_vertex r v :: l).Nodup := hrot.perm.nodup_iff.1 (hR.routes r).nodup
  refine ⟨upd A r (s.get_next_vertex r v :: l), f1, f2, ?_, fun t B hB hCB hm hrel => ?_⟩
  · intro r2 h2
    have hne : r2 ≠ r := fun e => hp (by rw [h2, e])
    rw [upd_other _ _ _ _ hne]
    exact hpend r2 h2
  · rw [f3] at hrel
    rw [f4] at hm
    have hBr : B r ~r (s.get_next_vertex r v :: l) := by
      have := hrel.route hp
      rw [upd_same] at this
      exact this.symm
    have hvB : v ∉ B r := fun h => (List.nodup_cons.1 hnd).1 (hBr.mem_iff.1 h)
    have hptr : v ≠ 0 → (t.customers_list v).route_ptr = 0 := by
      intro hv0
      refine hB.route_ptr_zero2 hvB (hrel.not_mem (r := r) (fun q hq => ?_)) hv0
      rw [upd_other _ _ _ _ hq]
      exact hR.not_mem_others hv hv0 q hq
    obtain ⟨t2, e, g1, g2, g3, g4⟩ := undo_remove fuel hB hCB hBr hvB hptr ((hR.routes r).range v hv)
    have hrel2 : Rel p A (upd B r (v :: s.get_next_vertex r v :: l)) s.routes_pool
        t2.routes_pool := by
      rw [g3]
      exact Rel.update (C := upd A r (s.get_next_vertex r v :: l))
        (by rw [upd_same]; exact hrel) hp hrot
    obtain ⟨t0, B0, e0, k⟩ := hback t2 _ g1 g2 (by rw [g4, hm]) hrel2
    refine ⟨t0, B0, ?_, k⟩
    rw [(Solution.remove_vertex_lists I s true r v).2]
    simp only [if_true]
    rw [apply_actions_snoc, e]
    exact e0

theorem Rewinds_insert (hw : Rewinds I fuel s0 A0 p s A) {r : Nat} {w v : Int}
    (hl : s.linked r w)
    (hv : (v = 0 ∧ (s.routes_list r).first_customer = -1) ∨
      (0 < v ∧ v < (I.vertices_num : Int) ∧ (s.customers_list v).route_ptr = 0))
    (hp : p ≠ some r) :
    ∃ A2, Rewinds I fuel s0 A0 p (Solution.insert_vertex_before I s true r w v) A2 := by
  obtain ⟨hR, hC, hpend, hback⟩ := hw
  have hwm := (hR.linked_iff r w).1 hl
  obtain ⟨l, hrot⟩ := exists_rotated_cons hwm
  have hr0 : r ≠ 0 := Nat.pos_iff_ne_zero.1 (hR.bound r (List.ne_nil_of_mem hwm)).1
  have hvA : v ∉ A r := by
    intro hm
    rcases hv with ⟨h1, h2⟩ | ⟨h1, _, h3⟩
    · subst h1
      have := (hR.linked_iff r 0).2 hm
      unfold Solution.linked at this
      simp only [if_true] at this
      exact this.2 h2
    · have := ((hR.routes r).mem_iff v (ne_of_gt h1)).1 hm
      exact hr0 (this.1.symm.trans h3)
  have hv1 : v ≠ 0 → (s.customers_list v).route_ptr = 0 := by
    intro hv0
    rcases hv with ⟨h1, _⟩ | ⟨_, _, h3⟩
    · exact absurd h1 hv0
    · exact h3
  have hrange : 0 ≤ v ∧ v < (I.vertices_num : Int) := by
    rcases hv with ⟨h1, _⟩ | ⟨h1, h2, _⟩
    · subst h1
      exact (hR.routes r).range w hwm |>.imp_left (fun _ => le_refl _) |>.imp_right
        (fun h => lt_of_le_of_lt ((hR.routes r).range w hwm).1 h)
    · exact ⟨le_of_lt h1, h2⟩
  obtain ⟨f1, f2, f3, f4⟩ := insert_vertex_ok2 true hR hC hrot hvA hv1 hrange
  refine ⟨upd A r (v :: w :: l), f1, f2, ?_, fun t B hB hCB hm hrel => ?_⟩
  · intro r2 h2
    have hne : r2 ≠ r := fun e => hp (by rw [h2, e])
    rw [upd_other _ _ _ _ hne]
    exact hpend r2 h2
  · rw [f3] at hrel
    rw [f4] at hm
    have hBr : B r ~r (v :: w :: l) := by
      have := hrel.route hp
      rw [upd_same] at this
      exact this.symm
    obtain ⟨t2, e, g1, g2, g3, g4⟩ := undo_insert fuel hB hCB hBr (by simp)
    have hrel2 : Rel p A (upd B r (w :: l)) s.routes_pool t2.routes_pool := by
      rw [g3]
      exact Rel.update (C := upd A r (v :: w :: l)) (by rw [upd_same]; exact hrel) hp hrot
    obtain ⟨t0, B0, e0, k⟩ := hback t2 _ g1 g2 (by rw [g4, hm]) hrel2
    refine ⟨t0, B0, ?_, k⟩
    rw [(Solution.insert_vertex_lists I s true r w v).2]
    simp only [if_true]
    rw [apply_actions_snoc, e]
    exact e0

theorem Rewinds_reverse (hsym : CostSym I) (hf : I.vertices_num ≤ fuel)
    (hw : Rewinds I fuel s0 A0 p s A) {r : Nat} {a b : Int} {s2 : Solution}
    (hla : s.linked r a) (hlb : s.linked r b) (hab : a ≠ b) (hpre : s.get_prev_vertex r a ≠ b)
    (hrun : Solution.reverse_route_path I s true r a b fuel = some s2) (hp : p ≠ some r) :
    ∃ A2, Rewinds I fuel s0 A0 p s2 A2 := by
  obtain ⟨hR, hC, hpend, hback⟩ := hw
  have ha := (hR.linked_iff r a).1 hla
  have hb := (hR.linked_iff r b).1 hlb
  obtain ⟨xs, ys, hrot, hx, hlast⟩ := exists_path_of_mem ha hb hab
  have hlen : xs.length < fuel := by
    have h1 := hR.length_le r
    have h2 := hrot.perm.length_eq
    simp only [List.length_cons, List.length_append] at h2
    omega
  obtain ⟨y, ys2, rfl⟩ : ∃ y ys2, ys = y :: ys2 := by
    cases ys with
    | nil =>
      exfalso
      have := (prev_of_rep hR hrot).1
      rw [List.append_nil, hlast] at this
      exact hpre this
    | cons y ys2 => exact ⟨y, ys2, rfl⟩
  obtain ⟨s4, e4, f1, f2, _, f4, f5, f6⟩ := reverse_ok true hsym hR hrot hx hlast hlen
  rw [hrun] at e4
  obtain rfl := Option.some.inj e4
  have fC : CostOK I s2 (upd A r ((a :: xs).reverse ++ y :: ys2)) := by
    refine CostOK_update_rot hR hC hrot (by simp) f6 ?_
    rw [f2]; simp
  refine ⟨upd A r ((a :: xs).reverse ++ y :: ys2), f1, fC, ?_, fun t B hB hCB hm hrel => ?_⟩
  · intro r2 h2
    have hne : r2 ≠ r := fun e => hp (by rw [h2, e])
    rw [upd_other _ _ _ _ hne]
    exact hpend r2 h2
  · rw [f5] at hrel
    rw [f6] at hm
    have hBr : B r ~r ((a :: xs).reverse ++ y :: ys2) := by
      have := hrel.route hp
      rw [upd_same] at this
      exact this.symm
    obtain ⟨t2, e, g1, g2, g3, g4⟩ := undo_reverse hsym hB hCB hBr hx hlast hlen
    have hrel2 : Rel p A (upd B r (a :: (xs ++ y :: ys2))) s.routes_pool t2.routes_pool := by
      rw [g3]
      exact Rel.update (C := upd A r ((a :: xs).reverse ++ y :: ys2))
        (by rw [upd_same]; exact hrel) hp hrot
    obtain ⟨t0, B0, e0, k⟩ := hback t2 _ g1 g2 (by rw [g4, hm]) hrel2
    refine ⟨t0, B0, ?_, k⟩
    rw [f4]
    simp only [if_true]
    rw [apply_actions_snoc, e]
    exact e0

theorem Rewinds_build (hsym : CostSym I) (hw : Rewinds I fuel s0 A0 none s A) {c : Int}
    (h1 : 0 < c) (h2 : c < (I.vertices_num : Int)) (hun : (s.customers_list c).route_ptr = 0)
    (hpool : s.routes_pool.begin < s.routes_pool.capacity) :
    ∃ A2, Rewinds I fuel s0 A0 none (Solution.build_one_customer_route I s true c).2 A2 := by
  obtain ⟨hR, hC, _, hback⟩ := hw
  have f1 := build_rep true hsym hR ⟨h1, h2⟩ hun hpool
  have f2 := build_costOK true (c := c) hsym hR hC hpool
  obtain ⟨_, e2, e3, e4, e5, _⟩ := Solution.build_scalars I s true c
  have hrho := Solution.build_route_eq I s true c
  have habs := (hR.pool_absent s.routes_pool.begin (le_refl _) hpool).1
  rw [← hrho] at habs
  refine ⟨_, f1, f2, (fun r h => by cases h), fun t B hB hCB hm hrel => ?_⟩
  obtain ⟨hrot, hpe⟩ := hrel
  have hBr : B (Solution.build_one_customer_route I s true c).1 ~r [0, c] := by
    have := hrot (Solution.build_one_customer_route I s true c).1
    rw [upd_same] at this
    exact this.symm
  obtain ⟨t2, e, g1, g2, g3, g4⟩ := undo_build fuel hsym hB hCB hBr
  have hrel2 : Rel none A (upd B (Solution.build_one_customer_route I s true c).1 [])
      s.routes_pool t2.routes_pool := by
    refine ⟨fun q => ?_, ?_⟩
    · by_cases e : q = (Solution.build_one_customer_route I s true c).1
      · rw [e, upd_same, habs]
      · have := hrot q
        rwa [upd_other _ _ _ _ e, ← upd_other B _ [] q e] at this
    · obtain ⟨p1, p2, p3⟩ := hpe
      rw [g3]
      rw [e3] at p1
      rw [e4] at p2
      rw [e5] at p3
      refine ⟨?_, p2, fun i hi1 hi2 => ?_⟩
      · simp only [FixedSizeValueStack.push]; omega
      · simp only [FixedSizeValueStack.push] at hi1 hi2 ⊢
        by_cases ei : i = t.routes_pool.begin - 1
        · rw [ei, upd_same, hrho]
          congr 1
          omega
        · rw [upd_other _ _ _ _ ei]
          exact p3 i (by omega) hi2
  obtain ⟨t0, B0, e0, k⟩ := hback t2 _ g1 g2 (by rw [g4, hm, e2]) hrel2
  refine ⟨t0, B0, ?_, k⟩
  rw [(Solution.build_lists I s true c).2]
  simp only [if_true]
  rw [apply_actions_snoc, e]
  exact e0

/-- A customer whose successor and predecessor are the depot is alone on its route. -/
theorem single_customer_cycle (hR : Rep I s A) {r : Nat} {c : Int} {l : List Int}
    (hrot : A r ~r (c :: 0 :: l)) (hprev : s.get_prev_vertex r c = 0) : l = [] := by
  have hnd : (c :: 0 :: l).Nodup := hrot.perm.nodup_iff.1 (hR.routes r).nodup
  by_contra hl2
  have h1 := (prev_of_rep hR hrot).1
  rw [hprev, lastFrom_cons] at h1
  have h2 := lastFrom_mem_of_ne_nil 0 l hl2
  rw [← h1] at h2
  exact (List.nodup_cons.1 (List.nodup_cons.1 hnd).2).1 h2

theorem Rewinds_empty (hsym : CostSym I) (hw : Rewinds I fuel s0 A0 none s A) {r : Nat} {c : Int}
    (hc0 : c ≠ 0) (hl : s.linked r c) (hn : (s.customers_list c).next = 0)
    (hpv : (s.customers_list c).prev = 0) :
    ∃ A2, Rewinds I fuel s0 A0 (some r) (Solution.remove_vertex I s true r c).1 A2 := by
  obtain ⟨hR, hC, _, hback⟩ := hw
  have hc := (hR.linked_iff r c).1 hl
  have hnext : s.get_next_vertex r c = 0 := by rw [Solution.get_next_vertex_ne s r hc0, hn]
  have hprev : s.get_prev_vertex r c = 0 := by rw [Solution.get_prev_vertex_ne s r hc0, hpv]
  obtain ⟨l, hrot⟩ := exists_rotated_next hR hc (by rw [hnext]; exact fun e => hc0 e.symm)
  rw [hnext] at hrot
  obtain rfl : l = [] := single_customer_cycle hR hrot hprev
  obtain ⟨f1, f2, f3, f4⟩ := remove_vertex_ok2 true hR hC hrot (by simp)
  have hrange := (hR.routes r).range c hc
  refine ⟨upd A r [0], f1, f2, ?_, fun t B hB hCB hm hrel => ?_⟩
  · intro r2 h2
    obtain rfl := Option.some.inj h2
    rw [upd_same]
  · rw [f3] at hrel
    rw [f4] at hm
    obtain ⟨_, hBr, hrot2, p1, p2, p3⟩ := hrel
    simp only [FixedSizeValueStack.push] at p1 p2 p3
    have hple := hR.pool_le
    have hptr : (t.customers_list c).route_ptr = 0 := by
      refine hB.route_ptr_zero2 (r := r) (by rw [hBr]; simp) (fun q hq hm2 => ?_) hc0
      have := (hrot2 q hq).mem_iff.2 hm2
      rw [upd_other _ _ _ _ hq] at this
      exact hR.not_mem_others hc hc0 q hq this
    have htop : t.routes_pool.array t.routes_pool.begin = r := by
      rw [p3 _ (le_refl _) (by omega), p1, upd_same]
    obtain ⟨t2, e, g1, g2, g3, g4⟩ := undo_empty fuel hsym hB hCB hBr
      ⟨lt_of_le_of_ne hrange.1 (fun e => hc0 e.symm), hrange.2⟩ hptr (by omega) htop
    have hrel2 : Rel none A (upd B r [0, c]) s.routes_pool t2.routes_pool := by
      refine ⟨fun q => ?_, ?_⟩
      · by_cases e : q = r
        · subst e
          rw [upd_same]
          exact hrot.trans ⟨1, rfl⟩
        · have := hrot2 q e
          rwa [upd_other _ _ _ _ e, ← upd_other B r [0, c] q e] at this
      · rw [g3]
        refine ⟨?_, p2, fun i hi1 hi2 => ?_⟩
        · simp only [FixedSizeValueStack.get]; omega
        · simp only [FixedSizeValueStack.get] at hi1 hi2 ⊢
          rw [p3 i (by omega) hi2, upd_other _ _ _ _ (by omega)]
    obtain ⟨t0, B0, e0, k⟩ := hback t2 _ g1 g2 (by rw [g4, hm]) hrel2
    refine ⟨t0, B0, ?_, k⟩
    rw [(Solution.remove_vertex_lists I s true r c).2, hnext]
    simp only [if_true]
    rw [apply_actions_snoc, e]
    exact e0

theorem Rewinds_remove_route (hsym : CostSym I) {r : Nat}
    (hw : Rewinds I fuel s0 A0 (some r) s A) :
    ∃ A2, Rewinds I fuel s0 A0 none (s.remove_route true r) A2 := by
  obtain ⟨hR, hC, hpend, hback⟩ := hw
  have hA := hpend r rfl
  have f1 := remove_route_rep true hR hA
  have f2 := remove_route_costOK true hsym hR hC hA
  obtain ⟨_, e2, e3, _⟩ := Solution.remove_route_scalars s true r
  refine ⟨upd A r [], f1, f2, (fun q h => by cases h), fun t B hB hCB hm hrel => ?_⟩
  obtain ⟨hrot, hpe⟩ := hrel
  rw [e3] at hpe
  rw [e2] at hm
  have hBr : B r = [] := by
    have := hrot r
    rw [upd_same] at this
    exact (List.isRotated_nil_iff'.1 this).symm
  have hrel2 : Rel (some r) A B s.routes_pool t.routes_pool := by
    refine ⟨hA, hBr, fun q hq => ?_, hpe⟩
    have := hrot q
    rwa [upd_other _ _ _ _ hq] at this
  obtain ⟨t0, B0, e0, k⟩ := hback t B hB hCB hm hrel2
  refine ⟨t0, B0, ?_, k⟩
  rw [(Solution.remove_route_lists s true r).2]
  simp only [if_true]
  rw [apply_actions_snoc]
  have : Solution.apply_action I t (Action.create_route r) fuel = some t := by
    simp [Solution.apply_action, Action.create_route]
  rw [this]
  exact e0

/-- Every state of a recorded trajectory can be rewound. -/
theorem Traj.rewinds (hsym : CostSym I) (hf : I.vertices_num ≤ fuel) (hR : Rep I s0 A0)
    (hC : CostOK I s0 A0) (h0 : s0.undo_list1 = []) {p : Option Nat} {s : Solution}
    (ht : Traj I fuel s0 p s) : ∃ A, Rewinds I fuel s0 A0 p s A := by
  induction ht with
  | start => exact ⟨A0, Rewinds_start hR hC h0⟩
  | build c _ h1 h2 h3 h4 ih =>
    obtain ⟨A, hw⟩ := ih
    exact Rewinds_build hsym hw h1 h2 h3 h4
  | remove r v _ h1 h2 h3 ih =>
    obtain ⟨A, hw⟩ := ih
    exact Rewinds_remove hw h1 h2 h3
  | insert r w v _ h1 h2 h3 ih =>
    obtain ⟨A, hw⟩ := ih
    exact Rewinds_insert hw h1 h2 h3
  | reverse r a b _ h1 h2 h3 h4 h5 h6 ih =>
    obtain ⟨A, hw⟩ := ih
    exact Rewinds_reverse hsym hf hw h1 h2 h3 h4 h5 h6
  | empty r c _ h1 h2 h3 h4 ih =>
    obtain ⟨A, hw⟩ := ih
    exact Rewinds_empty hsym hw h1 h2 h3 h4
  | remove_route r _ ih =>
    obtain ⟨A, hw⟩ := ih
    exact Rewinds_remove_route hsym hw

end Rewind

/-! ## Replaying the do list of a recorded trajectory -/

section Replay

variable {I : Instance} {fuel : Nat} {s0 s : Solution} {A0 A : Nat → List Int}

theorem apply_actions_append_one (l : List Action) (d : Action) (t : Solution) :
    Solution.apply_actions I fuel (l ++ [d]) t =
      (Solution.apply_actions I fuel l t).bind (fun x => Solution.apply_action I x d fuel) := by
  induction l generalizing t with
  | nil =>
    simp only [List.nil_append, Solution.apply_actions, Option.some_bind]
    cases Solution.apply_action I t d fuel <;> rfl
  | cons a l ih =>
    simp only [List.cons_append, Solution.apply_actions]
    cases Solution.apply_action I t a fuel with
    | none => rfl
    | some t1 => exact ih t1

theorem Replays_start (hR : Rep I s0 A0) (hC : CostOK I s0 A0) (h0 : s0.do_list1 = []) :
    Replays I fuel s0 A0 s0 A0 := by
  refine ⟨hR, hC, fun t0 B0 hB hCB hm hrot hpe => ?_⟩
  rw [h0]
  exact ⟨t0, B0, rfl, hB, hCB, hrot, hm, hpe⟩

/-- One more recorded action: if the action replayed on a state related to `s` gives a
state related to `s2`, then `s2` can be replayed. -/
theorem Replays_step {s2 : Solution} {A2 : Nat → List Int} {d : Action}
    (hw : Replays I fuel s0 A0 s A) (hR2 : Rep I s2 A2) (hC2 : CostOK I s2 A2)
    (hlist : s2.do_list1 = s.do_list1 ++ [d])
    (hstep : ∀ t B, Rep I t B → CostOK I t B → (∀ q, A q ~r B q) →
      t.max_number_routes = s.max_number_routes → PoolEq t.routes_pool s.routes_pool →
      ∃ t2 B2, Solution.apply_action I t d fuel = some t2 ∧ Rep I t2 B2 ∧ CostOK I t2 B2 ∧
        (∀ q, A2 q ~r B2 q) ∧ t2.max_number_routes = s2.max_number_routes ∧
        PoolEq t2.routes_pool s2.routes_pool) :
    Replays I fuel s0 A0 s2 A2 := by
  obtain ⟨_, _, hfwd⟩ := hw
  refine ⟨hR2, hC2, fun t0 B0 hB hCB hm hrot hpe => ?_⟩
  obtain ⟨t, B, e, g1, g2, g3, g4, g5⟩ := hfwd t0 B0 hB hCB hm hrot hpe
  obtain ⟨t2, B2, e2, k⟩ := hstep t B g1 g2 g3 g4 g5
  refine ⟨t2, B2, ?_, k⟩
  rw [hlist, apply_actions_append_one, e]
  exact e2

theorem Replays_remove (hw : Replays I fuel s0 A0 s A) {r : Nat} {v : Int}
    (hl : s.linked r v) (hn : s.get_next_vertex r v ≠ v) :
    ∃ l, A r ~r (v :: s.get_next_vertex r v :: l) ∧
      Replays I fuel s0 A0 (Solution.remove_vertex I s true r v).1
        (upd A r (s.get_next_vertex r v :: l)) := by
  have hR := hw.1
  have hC := hw.2.1
  have hv := (hR.linked_iff r v).1 hl
  obtain ⟨l, hrot⟩ := exists_rotated_next hR hv hn
  obtain ⟨f1, f2, f3, f4⟩ := remove_vertex_ok2 true hR hC hrot (by simp)
  refine ⟨l, hrot, Replays_step (d := Action.remove_vertex r v) hw f1 f2 ?_ ?_⟩
  · rw [(Solution.remove_vertex_lists I s true r v).1]; rfl
  · intro t B hB hCB hAB hm hpe
    obtain ⟨g1, g2, g3, g4⟩ := remove_vertex_ok2 false hB hCB ((hAB r).symm.trans hrot) (by simp)
    refine ⟨(Solution.remove_vertex I t false r v).1, _, ?_, g1, g2,
      isRotated_upd hAB r (List.IsRotated.refl _), by rw [g4, f4, hm], by rw [g3, f3]; exact hpe⟩
    simp [Solution.apply_action, Action.remove_vertex]

theorem Replays_insert (hw : Replays I fuel s0 A0 s A) {r : Nat} {w v : Int}
    (hl : s.linked r w)
    (hv : (v = 0 ∧ (s.routes_list r).first_customer = -1) ∨
      (0 < v ∧ v < (I.vertices_num : Int) ∧ (s.customers_list v).route_ptr = 0)) :
    ∃ l, Replays I fuel s0 A0 (Solution.insert_vertex_before I s true r w v) (upd A r l) := by
  have hR := hw.1
  have hC := hw.2.1
  have hwm := (hR.linked_iff r w).1 hl
  obtain ⟨l, hrot⟩ := exists_rotated_cons hwm
  have hr0 : r ≠ 0 := Nat.pos_iff_ne_zero.1 (hR.bound r (List.ne_nil_of_mem hwm)).1
  have hvA : v ∉ A r := by
    intro hm
    rcases hv with ⟨h1, h2⟩ | ⟨h1, _, h3⟩
    · subst h1
      have := (hR.linked_iff r 0).2 hm
      unfold Solution.linked at this
      simp only [if_true] at this
      exact this.2 h2
    · have := ((hR.routes r).mem_iff v (ne_of_gt h1)).1 hm
      exact hr0 (this.1.symm.trans h3)
  have hv1 : v ≠ 0 → (s.customers_list v).route_ptr = 0 := by
    intro hv0
    rcases hv with ⟨h1, _⟩ | ⟨_, _, h3⟩
    · exact absurd h1 hv0
    · exact h3
  have hrange : 0 ≤ v ∧ v < (I.vertices_num : Int) := by
    rcases hv with ⟨h1, _⟩ | ⟨h1, h2, _⟩
    · subst h1
      have := (hR.routes r).range w hwm
      exact ⟨le_refl _, lt_of_le_of_lt this.1 this.2⟩
    · exact ⟨le_of_lt h1, h2⟩
  obtain ⟨f1, f2, f3, f4⟩ := insert_vertex_ok2 true hR hC hrot hvA hv1 hrange
  refine ⟨v :: w :: l, Replays_step (d := Action.insert_vertex r w v) hw f1 f2 ?_ ?_⟩
  · rw [(Solution.insert_vertex_lists I s true r w v).1]; rfl
  · intro t B hB hCB hAB hm hpe
    have hBr : B r ~r (w :: l) := (hAB r).symm.trans hrot
    have hvB : v ∉ B r := fun h => hvA ((hAB r).mem_iff.2 h)
    have hpt : v ≠ 0 → (t.customers_list v).route_ptr = 0 := fun hv0 => by
      rw [Rep.route_ptr_eq hR hB hAB v hv0]; exact hv1 hv0
    obtain ⟨g1, g2, g3, g4⟩ := insert_vertex_ok2 false hB hCB hBr hvB hpt hrange
    have hp : t.is_route_in_solution r = true :=
      (hB.routes r).present_iff.1 ((isRotated_ne_nil hBr).2 (by simp))
    refine ⟨Solution.insert_vertex_before I t false r w v, _, ?_, g1, g2,
      isRotated_upd hAB r (List.IsRotated.refl _), by rw [g4, f4, hm], by rw [g3, f3]; exact hpe⟩
    simp [Solution.apply_action, Action.insert_vertex, hp]

theorem Replays_reverse (hsym : CostSym I) (hf : I.vertices_num ≤ fuel)
    (hw : Replays I fuel s0 A0 s A) {r : Nat} {a b : Int} {s2 : Solution}
    (hla : s.linked r a) (hlb : s.linked r b) (hab : a ≠ b) (hpre : s.get_prev_vertex r a ≠ b)
    (hrun : Solution.reverse_route_path I s true r a b fuel = some s2) :
    ∃ l, Replays I fuel s0 A0 s2 (upd A r l) := by
  have hR := hw.1
  have hC := hw.2.1
  have ha := (hR.linked_iff r a).1 hla
  have hb := (hR.linked_iff r b).1 hlb
  obtain ⟨xs, ys, hrot, hx, hlast⟩ := exists_path_of_mem ha hb hab
  have hlen : xs.length < fuel := by
    have h1 := hR.length_le r
    have h2 := hrot.perm.length_eq
    simp only [List.length_cons, List.length_append] at h2
    omega
  obtain ⟨y, ys2, rfl⟩ : ∃ y ys2, ys = y :: ys2 := by
    cases ys with
    | nil =>
      exfalso
      have := (prev_of_rep hR hrot).1
      rw [List.append_nil, hlast] at this
      exact hpre this
    | cons y ys2 => exact ⟨y, ys2, rfl⟩
  obtain ⟨s4, e4, f1, f2, f3, _, f5, f6⟩ := reverse_ok true hsym hR hrot hx hlast hlen
  rw [hrun] at e4
  obtain rfl := Option.some.inj e4
  have fC : CostOK I s2 (upd A r ((a :: xs).reverse ++ y :: ys2)) := by
    refine CostOK_update_rot hR hC hrot (by simp) f6 ?_
    rw [f2]; simp
  refine ⟨(a :: xs).reverse ++ y :: ys2,
    Replays_step (d := Action.reverse_route_path r a b) hw f1 fC ?_ ?_⟩
  · rw [f3]; rfl
  · intro t B hB hCB hAB hm hpe
    have hBr : B r ~r (a :: (xs ++ y :: ys2)) := (hAB r).symm.trans hrot
    obtain ⟨t2, e, g1, g2, _, _, g5, g6⟩ := reverse_ok false hsym hB hBr hx hlast hlen
    have gC : CostOK I t2 (upd B r ((a :: xs).reverse ++ y :: ys2)) := by
      refine CostOK_update_rot hB hCB hBr (by simp) g6 ?_
      rw [g2]; simp
    refine ⟨t2, _, ?_, g1, gC, isRotated_upd hAB r (List.IsRotated.refl _),
      by rw [g6, f6, hm], by rw [g5, f5]; exact hpe⟩
    simpa [Solution.apply_action, Action.reverse_route_path] using e

theorem Replays_build (hsym : CostSym I) (hw : Replays I fuel s0 A0 s A) {c : Int}
    (h1 : 0 < c) (h2 : c < (I.vertices_num : Int)) (hun : (s.customers_list c).route_ptr = 0)
    (hpool : s.routes_pool.begin < s.routes_pool.capacity) :
    ∃ A2, Replays I fuel s0 A0 (Solution.build_one_customer_route I s true c).2 A2 := by
  have hR := hw.1
  have hC := hw.2.1
  have f1 := build_rep true hsym hR ⟨h1, h2⟩ hun hpool
  have f2 := build_costOK true (c := c) hsym hR hC hpool
  obtain ⟨_, e2, e3, e4, e5, _⟩ := Solution.build_scalars I s true c
  refine ⟨_, Replays_step hw f1 f2 (d := Action.create_one_customer_route
    (Solution.build_one_customer_route I s true c).1 c) ?_ ?_⟩
  · rw [(Solution.build_lists I s true c).1]; rfl
  · intro t B hB hCB hAB hm hpe
    obtain ⟨p1, p2, p3⟩ := hpe
    have hpt : t.routes_pool.begin < t.routes_pool.capacity := by rw [p1, p2]; exact hpool
    have hun2 : (t.customers_list c).route_ptr = 0 := by
      rw [Rep.route_ptr_eq hR hB hAB c (ne_of_gt h1)]; exact hun
    have g1 := build_rep false hsym hB ⟨h1, h2⟩ hun2 hpt
    have g2 := build_costOK false (c := c) hsym hB hCB hpt
    obtain ⟨_, k2, k3, k4, k5, _⟩ := Solution.build_scalars I t false c
    have hrho : (Solution.build_one_customer_route I t false c).1 =
        (Solution.build_one_customer_route I s true c).1 := by
      rw [Solution.build_route_eq, Solution.build_route_eq, p3 _ (le_refl _) hpt, p1]
    rw [hrho] at g1 g2
    refine ⟨(Solution.build_one_customer_route I t false c).2, _, ?_, g1, g2,
      isRotated_upd hAB _ (List.IsRotated.refl _), by rw [k2, e2, hm], ?_⟩
    · simp [Solution.apply_action, Action.create_one_customer_route]
    · refine ⟨by rw [k3, e3, p1], by rw [k4, e4, p2], fun i hi1 hi2 => ?_⟩
      rw [k3] at hi1
      rw [k4] at hi2
      rw [k5, e5]
      exact p3 i (by omega) hi2

theorem Replays_remove_route (hsym : CostSym I) (hw : Replays I fuel s0 A0 s A) {r : Nat}
    (hA : A r = [0]) :
    ∃ A2, Replays I fuel s0 A0 (s.remove_route true r) A2 := by
  have hR := hw.1
  have hC := hw.2.1
  have f1 := remove_route_rep true hR hA
  have f2 := remove_route_costOK true hsym hR hC hA
  obtain ⟨_, e2, e3, _⟩ := Solution.remove_route_scalars s true r
  refine ⟨upd A r [], Replays_step (d := Action.remove_route r) hw f1 f2 ?_ ?_⟩
  · rw [(Solution.remove_route_lists s true r).1]; rfl
  · intro t B hB hCB hAB hm hpe
    have hBr : B r = [0] := by
      have := hAB r
      rw [hA] at this
      exact List.isRotated_singleton_iff'.1 this |>.symm
    have g1 := remove_route_rep false hB hBr
    have g2 := remove_route_costOK false hsym hB hCB hBr
    obtain ⟨_, k2, k3, _⟩ := Solution.remove_route_scalars t false r
    obtain ⟨p1, p2, p3⟩ := hpe
    refine ⟨t.remove_route false r, _, ?_, g1, g2, isRotated_upd hAB r (List.IsRotated.refl _),
      by rw [k2, e2, hm], ?_⟩
    · simp [Solution.apply_action, Action.remove_route]
    · rw [k3, e3]
      refine ⟨?_, p2, fun i hi1 hi2 => ?_⟩
      · simp only [FixedSizeValueStack.push]; omega
      · simp only [FixedSizeValueStack.push] at hi1 hi2 ⊢
        rw [p1]
        by_cases ei : i = s.routes_pool.begin - 1
        · rw [ei, upd_same, upd_same]
        · rw [upd_other _ _ _ _ ei, upd_other _ _ _ _ ei]
          exact p3 i (by omega) hi2

/-- Every state of a recorded trajectory can be replayed; between the `remove_vertex` that
has emptied route `r` and `remove_route(r)` the route is described by `[0]`. -/
theorem Traj.replays (hsym : CostSym I) (hf : I.vertices_num ≤ fuel) (hR : Rep I s0 A0)
    (hC : CostOK I s0 A0) (h0 : s0.do_list1 = []) {p : Option Nat} {s : Solution}
    (ht : Traj I fuel s0 p s) :
    ∃ A, Replays I fuel s0 A0 s A ∧ ∀ r, p = some r → A r = [0] := by
  induction ht with
  | start => exact ⟨A0, Replays_start hR hC h0, fun r h => by cases h⟩
  | build c _ h1 h2 h3 h4 ih =>
    obtain ⟨A, hw, _⟩ := ih
    obtain ⟨A2, h⟩ := Replays_build hsym hw h1 h2 h3 h4
    exact ⟨A2, h, fun r h => by cases h⟩
  | @remove p s r v _ h1 h2 h3 ih =>
    obtain ⟨A, hw, hpend⟩ := ih
    obtain ⟨l, _, h⟩ := Replays_remove hw h1 h2
    refine ⟨_, h, fun q hq => ?_⟩
    rw [upd_other _ _ _ _ (fun e => h3 (by rw [hq, e]))]
    exact hpend q hq
  | @insert p s r w v _ h1 h2 h3 ih =>
    obtain ⟨A, hw, hpend⟩ := ih
    obtain ⟨l, h⟩ := Replays_insert hw h1 h2
    refine ⟨_, h, fun q hq => ?_⟩
    rw [upd_other _ _ _ _ (fun e => h3 (by rw [hq, e]))]
    exact hpend q hq
  | @reverse p s s2 r a b _ h1 h2 h3 h4 h5 h6 ih =>
    obtain ⟨A, hw, hpend⟩ := ih
    obtain ⟨l, h⟩ := Replays_reverse hsym hf hw h1 h2 h3 h4 h5
    refine ⟨_, h, fun q hq => ?_⟩
    rw [upd_other _ _ _ _ (fun e => h6 (by rw [hq, e]))]
    exact hpend q hq
  | @empty s r c _ h1 h2 h3 h4 ih =>
    obtain ⟨A, hw, _⟩ := ih
    have hnext : s.get_next_vertex r c = 0 := by rw [Solution.get_next_vertex_ne s r h1, h3]
    have hprev : s.get_prev_vertex r c = 0 := by rw [Solution.get_prev_vertex_ne s r h1, h4]
    obtain ⟨l, hrot, h⟩ := Replays_remove hw h2 (by rw [hnext]; exact fun e => h1 e.symm)
    rw [hnext] at hrot h
    obtain rfl : l = [] := single_customer_cycle hw.1 hrot hprev
    refine ⟨_, h, fun q hq => ?_⟩
    obtain rfl := Option.some.inj hq
    rw [upd_same]
  | remove_route r _ ih =>
    obtain ⟨A, hw, hpend⟩ := ih
    obtain ⟨A2, h⟩ := Replays_remove_route hsym hw (hpend r rfl)
    exact ⟨A2, h, fun r h => by cases h⟩

end Replay

/-! ## The cache refines a list -/

theorem LChain_frame {cache cache2 : Int → Entry} : ∀ (l : List Int) (p : Int),
    (∀ x ∈ l, cache2 x = cache x) → LChain cache p l → LChain cache2 p l
  | [], _, _, _ => trivial
  | x :: rest, p, h, hc => by
    obtain ⟨h1, h2, h3, h4⟩ := hc
    have hx := h x (List.mem_cons_self _ _)
    exact ⟨by rw [hx]; exact h1, by rw [hx]; exact h2, by rw [hx]; exact h3,
      LChain_frame rest x (fun y hy => h y (List.mem_cons_of_mem _ hy)) h4⟩

theorem LChain_used {cache : Int → Entry} : ∀ (l : List Int) (p : Int),
    LChain cache p l → ∀ x ∈ l, (cache x).used = true
  | [], _, _, x, hx => by cases hx
  | y :: rest, _, hc, x, hx => by
    rcases List.mem_cons.1 hx with rfl | hx
    · exact hc.2.1
    · exact LChain_used rest y hc.2.2.2 x hx

theorem LChain_mid {cache : Int → Entry} {v : Int} {b : List Int} : ∀ (a : List Int) (p : Int),
    LChain cache p (a ++ v :: b) →
    (cache v).prev = a.getLastD p ∧ (cache v).next = b.headD (-1) ∧ LChain cache v b
  | [], _, hc => ⟨hc.1, hc.2.2.1, hc.2.2.2⟩
  | x :: a, _, hc => by
    rw [List.getLastD_cons]
    exact LChain_mid a x hc.2.2.2

theorem headD_mem_or (b : List Int) (d : Int) : b.headD d = d ∨ b.headD d ∈ b := by
  cases b with
  | nil => exact Or.inl rfl
  | cons y b => exact Or.inr (List.mem_cons_self _ _)

theorem getLastD_mem_or (a : List Int) (d : Int) : a.getLastD d = d ∨ a.getLastD d ∈ a := by
  cases a with
  | nil => exact Or.inl rfl
  | cons y a =>
    right
    rw [List.getLastD_cons]
    exact List.getLastD_mem_cons a y

namespace LRUCache

theorem remove_scalars (c : LRUCache) (v : Int) :
    (c.remove v).counter = c.counter ∧ (c.remove v).cache_size = c.cache_size ∧
    (c.remove v).head = (if (c.cache v).prev = -1 then (c.cache v).next else c.head) ∧
    (c.remove v).tail = (if (c.cache v).next = -1 then (c.cache v).prev else c.tail) := by
  unfold remove
  refine ⟨?_, ?_, ?_, ?_⟩ <;> dsimp only <;> split_ifs <;> rfl

theorem remove_cache_self (c : LRUCache) (v : Int) :
    (c.remove v).cache v = ⟨-1, -1, false⟩ := by
  unfold remove
  simp [upd]

theorem remove_cache_other (c : LRUCache) (v x : Int) (h1 : x ≠ v)
    (h2 : x ≠ (c.cache v).prev) (h3 : x ≠ (c.cache v).next) :
    (c.remove v).cache x = c.cache x := by
  unfold remove
  dsimp only
  split_ifs <;> simp [upd, h1, h2, h3]

theorem remove_cache_prev (c : LRUCache) (v x : Int) (h0 : x ≠ -1) (h1 : x ≠ v)
    (h2 : x = (c.cache v).prev) (h3 : x ≠ (c.cache v).next) :
    (c.remove v).cache x = { c.cache x with next := (c.cache v).next } := by
  subst h2
  unfold remove
  dsimp only
  split_ifs <;> simp_all [upd]

theorem remove_cache_next (c : LRUCache) (v x : Int) (h0 : x ≠ -1) (h1 : x ≠ v)
    (h2 : x ≠ (c.cache v).prev) (h3 : x = (c.cache v).next) :
    (c.remove v).cache x = { c.cache x with prev := (c.cache v).prev } := by
  subst h3
  unfold remove
  dsimp only
  split_ifs <;> simp_all [upd]

end LRUCache
namespace LRUCache

theorem remove_chain (c : LRUCache) (v : Int) (b : List Int) : ∀ (a : List Int) (p : Int),
    (a ++ v :: b).Nodup → (∀ x ∈ a ++ v :: b, x ≠ -1) → p ∉ a ++ v :: b →
    LChain c.cache p (a ++ v :: b) → LChain (c.remove v).cache p (a ++ b)
  | [], p, hnd, hval, hp, hc => by
    obtain ⟨hq, hn, hb⟩ := @LChain_mid c.cache v b [] p hc
    simp only [List.getLastD_nil] at hq
    simp only [List.nil_append] at hnd hval hp ⊢
    have hvb : v ∉ b := (List.nodup_cons.1 hnd).1
    have hndb : b.Nodup := (List.nodup_cons.1 hnd).2
    cases b with
    | nil => trivial
    | cons y b =>
      have hyv : y ≠ v := fun h => hvb (h ▸ List.mem_cons_self _ _)
      have hy1 : y ≠ -1 := hval y (by simp)
      have hyp : y ≠ p := fun h => hp (h ▸ by simp)
      have hyb : y ∉ b := (List.nodup_cons.1 hndb).1
      simp only [List.headD_cons] at hn
      have hy := remove_cache_next c v y hy1 hyv (by rw [hq]; exact hyp) hn.symm
      obtain ⟨h1, h2, h3, h4⟩ := hb
      refine ⟨by rw [hy]; exact hq, by rw [hy]; exact h2, by rw [hy]; exact h3, ?_⟩
      refine LChain_frame b y (fun x hx => ?_) h4
      have hxv : x ≠ v := fun h => hvb (h ▸ List.mem_cons_of_mem _ hx)
      have hxp : x ≠ p := fun h => hp (h ▸ by simp [hx])
      have hxy : x ≠ y := fun h => hyb (h ▸ hx)
      exact remove_cache_other c v x hxv (by rw [hq]; exact hxp) (by rw [hn]; exact hxy)
  | x :: a, p, hnd, hval, hp, hc => by
    obtain ⟨h1, h2, h3, h4⟩ := hc
    have hxr : x ∉ a ++ v :: b := (List.nodup_cons.1 hnd).1
    have hndr : (a ++ v :: b).Nodup := (List.nodup_cons.1 hnd).2
    have ih := remove_chain c v b a x hndr
      (fun y hy => hval y (List.mem_cons_of_mem _ hy)) hxr h4
    obtain ⟨hq, hn, hb⟩ := @LChain_mid c.cache v b a x h4
    have hx1 : x ≠ -1 := hval x (by simp)
    have hxv : x ≠ v := fun h => hxr (h ▸ by simp)
    have hxn : x ≠ (c.cache v).next := by
      rw [hn]
      rcases headD_mem_or b (-1) with h | h
      · rw [h]; exact hx1
      · exact fun e => hxr (e ▸ List.mem_append_right _ (List.mem_cons_of_mem _ h))
    refine ⟨?_, ?_, ?_, ih⟩
    · cases a with
      | nil =>
        rw [remove_cache_prev c v x hx1 hxv (by rw [hq]; rfl) hxn]
        exact h1
      | cons z a =>
        have hxq : x ≠ (c.cache v).prev := by
          rw [hq, List.getLastD_cons]
          exact fun e => hxr (e ▸ by
            have := List.getLastD_mem_cons a z
            simp only [List.cons_append, List.mem_cons, List.mem_append] at this ⊢
            tauto)
        rw [remove_cache_other c v x hxv hxq hxn]
        exact h1
    · cases a with
      | nil =>
        rw [remove_cache_prev c v x hx1 hxv (by rw [hq]; rfl) hxn]
        exact h2
      | cons z a =>
        have hxq : x ≠ (c.cache v).prev := by
          rw [hq, List.getLastD_cons]
          exact fun e => hxr (e ▸ by
            have := List.getLastD_mem_cons a z
            simp only [List.cons_append, List.mem_cons, List.mem_append] at this ⊢
            tauto)
        rw [remove_cache_other c v x hxv hxq hxn]
        exact h2
    · cases a with
      | nil =>
        rw [remove_cache_prev c v x hx1 hxv (by rw [hq]; rfl) hxn]
        simpa using hn
      | cons z a =>
        have hxq : x ≠ (c.cache v).prev := by
          rw [hq, List.getLastD_cons]
          exact fun e => hxr (e ▸ by
            have := List.getLastD_mem_cons a z
            simp only [List.cons_append, List.mem_cons, List.mem_append] at this ⊢
            tauto)
        rw [remove_cache_other c v x hxv hxq hxn]
        simpa using h3

end LRUCache
namespace LRUCache

theorem remove_links (c : LRUCache) (v : Int) (a b : List Int)
    (h : c.Links (a ++ v :: b)) : (c.remove v).Links (a ++ b) := by
  obtain ⟨hnd, hval, hch, hhead, htail, hun⟩ := h
  obtain ⟨hq, hn, hb⟩ := @LChain_mid c.cache v b a (-1) hch
  have hm1 : (-1 : Int) ∉ a ++ v :: b := fun h => hval _ h rfl
  have hsub : ∀ x, x ∈ a ++ b → x ∈ a ++ v :: b := by
    intro x hx
    simp only [List.mem_append, List.mem_cons] at hx ⊢
    tauto
  have hva : v ∉ a ∧ v ∉ b := by
    have := List.nodup_append.1 hnd
    have h2 := List.nodup_cons.1 this.2.1
    refine ⟨fun h => ?_, h2.1⟩
    exact this.2.2 h (List.mem_cons_self _ _) 
  obtain ⟨s1, s2, s3, s4⟩ := remove_scalars c v
  refine ⟨?_, fun x hx => hval x (hsub x hx), remove_chain c v b a (-1) hnd hval hm1 hch, ?_, ?_, ?_⟩
  · have := List.nodup_append.1 hnd
    refine List.nodup_append.2 ⟨this.1, (List.nodup_cons.1 this.2.1).2, ?_⟩
    intro x hx hxb
    exact this.2.2 hx (List.mem_cons_of_mem _ hxb)
  · rw [s3, hq, hn, hhead]
    cases a with
    | nil => simp
    | cons x a =>
      have : (x :: a).getLastD (-1) ≠ -1 := by
        rcases getLastD_mem_or (x :: a) (-1) with h | h
        · rw [List.getLastD_cons] at h ⊢
          exact fun _ => hval _ (List.mem_append_left _ (List.getLastD_mem_cons a x)) h
        · exact hval _ (List.mem_append_left _ h)
      rw [if_neg this]
      rfl
  · rw [s4, hq, hn, htail]
    cases b with
    | nil =>
      simp only [List.headD_nil, if_true, List.append_nil]
    | cons y b =>
      have : y ≠ -1 := hval y (by simp)
      simp only [List.headD_cons, if_neg this]
      simp [List.getLastD_eq_getLast?, List.getLast?_append, List.getLast?_cons_cons]
  · intro x hx
    by_cases hxv : x = v
    · rw [hxv, remove_cache_self]
    · have hx2 : x ∉ a ++ v :: b := by
        simp only [List.mem_append, List.mem_cons] at hx ⊢
        tauto
      have hxq : x ≠ (c.cache v).prev ∨ x = -1 := by
        rw [hq]
        rcases getLastD_mem_or a (-1) with h | h
        · by_cases hx1 : x = -1
          · exact Or.inr hx1
          · left; rw [h]; exact hx1
        · left
          exact fun e => hx2 (e ▸ List.mem_append_left _ h)
      have hxn : x ≠ (c.cache v).next ∨ x = -1 := by
        rw [hn]
        rcases headD_mem_or b (-1) with h | h
        · by_cases hx1 : x = -1
          · exact Or.inr hx1
          · left; rw [h]; exact hx1
        · left
          exact fun e => hx2 (e ▸ List.mem_append_right _ (List.mem_cons_of_mem _ h))
      have key : (c.remove v).cache x = c.cache x := by
        unfold remove
        dsimp only
        by_cases e1 : (c.cache v).prev = -1 <;> by_cases e2 : (c.cache v).next = -1
        · simp [e1, e2, upd, hxv]
        · have : x ≠ (c.cache v).next := by
            rcases hxn with h | h
            · exact h
            · rw [h]; exact fun e => e2 e.symm
          simp [e1, e2, upd, hxv, this]
        · have : x ≠ (c.cache v).prev := by
            rcases hxq with h | h
            · exact h
            · rw [h]; exact fun e => e1 e.symm
          simp [e1, e2, upd, hxv, this]
        · have h1 : x ≠ (c.cache v).prev := by
            rcases hxq with h | h
            · exact h
            · rw [h]; exact fun e => e1 e.symm
          have h2 : x ≠ (c.cache v).next := by
            rcases hxn with h | h
            · exact h
            · rw [h]; exact fun e => e2 e.symm
          simp [e1, e2, upd, hxv, h1, h2]
      rw [key]
      exact hun x hx2

end LRUCache
namespace LRUCache

theorem splay_scalars (c : LRUCache) (v : Int) :
    (c.splay_on_top v).counter = c.counter ∧ (c.splay_on_top v).cache_size = c.cache_size ∧
    (c.splay_on_top v).head = v ∧
    (c.splay_on_top v).tail = (if c.tail = -1 then v else c.tail) := by
  unfold splay_on_top
  refine ⟨?_, ?_, ?_, ?_⟩ <;> dsimp only <;> split_ifs <;> rfl

theorem splay_cache_self (c : LRUCache) (v : Int) (h : c.head ≠ v) :
    (c.splay_on_top v).cache v = ⟨-1, c.head, true⟩ := by
  unfold splay_on_top
  dsimp only
  split_ifs <;> simp [upd, h, Ne.symm h]

theorem splay_cache_head (c : LRUCache) (v : Int) (h : c.head ≠ v) (h1 : c.head ≠ -1) :
    (c.splay_on_top v).cache c.head = { c.cache c.head with prev := v } := by
  unfold splay_on_top
  dsimp only
  split_ifs <;> simp [upd, h, Ne.symm h]

theorem splay_cache_other (c : LRUCache) (v x : Int) (h : x ≠ v) (h1 : x ≠ c.head) :
    (c.splay_on_top v).cache x = c.cache x := by
  unfold splay_on_top
  dsimp only
  split_ifs <;> simp [upd, h, h1, Ne.symm h, Ne.symm h1]

theorem splay_links (c : LRUCache) (v : Int) (l : List Int) (h : c.Links l) (hv : v ∉ l)
    (hv1 : v ≠ -1) : (c.splay_on_top v).Links (v :: l) := by
  obtain ⟨hnd, hval, hch, hhead, htail, hun⟩ := h
  obtain ⟨s1, s2, s3, s4⟩ := splay_scalars c v
  have hhv : c.head ≠ v := by
    rw [hhead]
    rcases headD_mem_or l (-1) with h | h
    · rw [h]; exact fun e => hv1 e.symm
    · exact fun e => hv (e ▸ h)
  refine ⟨List.nodup_cons.2 ⟨hv, hnd⟩, ?_, ?_, ?_, ?_, ?_⟩
  · intro x hx
    rcases List.mem_cons.1 hx with rfl | hx
    · exact hv1
    · exact hval x hx
  · refine ⟨?_, ?_, ?_, ?_⟩
    · rw [splay_cache_self c v hhv]
    · rw [splay_cache_self c v hhv]
    · rw [splay_cache_self c v hhv]
      exact hhead
    · cases l with
      | nil => trivial
      | cons y l =>
        simp only [List.headD_cons] at hhead
        have hy1 : y ≠ -1 := hval y (by simp)
        have hy := splay_cache_head c v hhv (by rw [hhead]; exact hy1)
        rw [hhead] at hy
        obtain ⟨h1, h2, h3, h4⟩ := hch
        refine ⟨by rw [hy], by rw [hy]; exact h2, by rw [hy]; exact h3, ?_⟩
        refine LChain_frame l y (fun x hx => ?_) h4
        have hxv : x ≠ v := fun e => hv (e ▸ List.mem_cons_of_mem _ hx)
        have hxy : x ≠ y := fun e => (List.nodup_cons.1 hnd).1 (e ▸ hx)
        exact splay_cache_other c v x hxv (by rw [hhead]; exact hxy)
  · rw [s3]; rfl
  · rw [s4, htail, List.getLastD_cons]
    cases l with
    | nil => simp
    | cons y l =>
      have : (y :: l).getLastD (-1) ≠ -1 := by
        rw [List.getLastD_cons]
        exact hval _ (List.getLastD_mem_cons l y)
      rw [if_neg this]
      simp [List.getLastD_eq_getLast?, List.getLast?_eq_getLast _ (List.cons_ne_nil y l)]
  · intro x hx
    have hxv : x ≠ v := fun e => hx (e ▸ List.mem_cons_self _ _)
    have hxl : x ∉ l := fun e => hx (List.mem_cons_of_mem _ e)
    by_cases hxh : x = c.head
    · by_cases hh1 : c.head = -1
      · have : (c.splay_on_top v).cache x = c.cache x := by
          unfold splay_on_top
          dsimp only
          split_ifs <;> first | contradiction | simp [hh1, upd, hxv]
        rw [this]; exact hun x hxl
      · exfalso
        rw [hhead] at hxh hh1
        rcases headD_mem_or l (-1) with h | h
        · exact hh1 h
        · exact hxl (hxh ▸ h)
    · rw [splay_cache_other c v x hxv hxh]
      exact hun x hxl

theorem mem_of_used {c : LRUCache} {l : List Int} (h : c.Links l) {v : Int}
    (hv : (c.cache v).used = true) : v ∈ l := by
  by_contra hn
  have := h.unused v hn
  rw [this] at hv
  cases hv

theorem used_of_mem {c : LRUCache} {l : List Int} (h : c.Links l) {v : Int}
    (hv : v ∈ l) : (c.cache v).used = true :=
  LChain_used l (-1) h.chain v hv

end LRUCache

theorem filter_ne_append {v : Int} {a b : List Int} (ha : v ∉ a) (hb : v ∉ b) :
    (a ++ v :: b).filter (fun x => decide (x ≠ v)) = a ++ b := by
  have h1 : ∀ l : List Int, v ∉ l → l.filter (fun x => decide (x ≠ v)) = l := by
    intro l hl
    refine List.filter_eq_self.2 (fun x hx => ?_)
    have hxv : x ≠ v := fun e => hl (e ▸ hx)
    simpa using hxv
  rw [List.filter_append, List.filter_cons, h1 a ha, h1 b hb]
  simp

namespace LRUCache

/-- Method `insert` acts on the list held by the cache as `lruInsert` does. -/
theorem insert_holds (c : LRUCache) (H : Nat) (l : List Int) (v : Int) (h : c.Holds l)
    (hH : c.cache_size = H) (hH1 : 1 ≤ H) (hv : v ≠ -1) :
    (c.insert v).Holds (lruInsert H v l) ∧ (c.insert v).cache_size = H := by
  obtain ⟨hl, hcnt, hle⟩ := h
  unfold insert lruInsert
  by_cases hu : (c.cache v).used = true
  · have hm := mem_of_used hl hu
    obtain ⟨a, b, rfl⟩ := List.append_of_mem hm
    have hnd := List.nodup_append.1 hl.nodup
    have hva : v ∉ a := fun e => hnd.2.2 e (List.mem_cons_self _ _)
    have hvb : v ∉ b := (List.nodup_cons.1 hnd.2.1).1
    have hr := remove_links c v a b hl
    have hs := splay_links (c.remove v) v (a ++ b) hr (by simp [hva, hvb]) hv
    obtain ⟨s1, s2, s3, s4⟩ := splay_scalars (c.remove v) v
    obtain ⟨r1, r2, r3, r4⟩ := remove_scalars c v
    rw [if_pos hu, if_pos hm, filter_ne_append hva hvb]
    refine ⟨⟨hs, ?_, ?_⟩, ?_⟩
    · rw [s1, r1, hcnt]; simp; omega
    · rw [s2, r2]; simp at hle ⊢; omega
    · rw [s2, r2, hH]
  · have hm : v ∉ l := fun e => hu (used_of_mem hl e)
    rw [if_neg hu, if_neg hm]
    by_cases hfull : c.counter = c.cache_size
    · have hlen : l.length = H := by
        rw [hcnt, hH] at hfull
        exact_mod_cast hfull
      have hne : l ≠ [] := by
        intro e; rw [e] at hlen; simp at hlen; omega
      have hsplit : l = l.dropLast ++ [l.getLast hne] := (List.dropLast_append_getLast hne).symm
      have htail : c.tail = l.getLast hne := by
        rw [hl.tail_eq, List.getLastD_eq_getLast?, List.getLast?_eq_getLast l hne]
        rfl
      have hl2 := hl
      rw [hsplit] at hl2
      have hr := remove_links c (l.getLast hne) l.dropLast [] hl2
      rw [List.append_nil] at hr
      have hvd : v ∉ l.dropLast := fun e => hm (List.mem_of_mem_dropLast e)
      have hs := splay_links _ v _ hr hvd hv
      obtain ⟨s1, s2, s3, s4⟩ := splay_scalars (c.remove (l.getLast hne)) v
      obtain ⟨r1, r2, r3, r4⟩ := remove_scalars c (l.getLast hne)
      simp only [if_pos hfull, if_pos hlen, htail]
      refine ⟨⟨hs, ?_, ?_⟩, ?_⟩
      · rw [s1, r1, hcnt]
        simp only [List.length_cons, List.length_dropLast]
        have : 1 ≤ l.length := by omega
        omega
      · rw [s2, r2]
        simp only [List.length_cons, List.length_dropLast]
        have : 1 ≤ l.length := by omega
        omega
      · rw [s2, r2, hH]
    · have hlen : l.length ≠ H := by
        intro e
        apply hfull
        rw [hcnt, hH, e]
      have hl3 : c.Links l := hl
      have hs := splay_links { c with counter := c.counter + 1 } v l
        ⟨hl.nodup, hl.valid, hl.chain, hl.head_eq, hl.tail_eq, hl.unused⟩ hm hv
      obtain ⟨s1, s2, s3, s4⟩ := splay_scalars { c with counter := c.counter + 1 } v
      simp only [if_neg hfull, if_neg hlen]
      refine ⟨⟨hs, ?_, ?_⟩, ?_⟩
      · rw [s1]
        simp only [List.length_cons]
        push_cast
        omega
      · rw [s2]
        simp only [List.length_cons]
        push_cast
        have : (l.length : Int) ≠ H := by exact_mod_cast hlen
        omega
      · rw [s2]; exact hH

end LRUCache
namespace LRUCache

theorem clear_loop_spec : ∀ (l : List Int) (fuel : Nat) (c : LRUCache) (p : Int),
    l.Nodup → (∀ x ∈ l, x ≠ -1) → LChain c.cache p l → l.length < fuel →
    ∃ c1, clear_loop fuel c (l.headD (-1)) = some c1 ∧
      (∀ x, x ∈ l → (c1.cache x).used = false) ∧ (∀ x, x ∉ l → c1.cache x = c.cache x) ∧
      c1.counter = c.counter ∧ c1.cache_size = c.cache_size
  | [], fuel, c, p, _, _, _, hf => by
    obtain ⟨k, rfl⟩ : ∃ k, fuel = k + 1 := ⟨fuel - 1, by simp at hf; omega⟩
    exact ⟨c, by simp [clear_loop], (fun x hx => by cases hx), (fun x _ => rfl), rfl, rfl⟩
  | y :: l, fuel, c, p, hnd, hval, hch, hf => by
    obtain ⟨k, rfl⟩ : ∃ k, fuel = k + 1 := ⟨fuel - 1, by simp at hf; omega⟩
    have hy1 : y ≠ -1 := hval y (by simp)
    have hyl : y ∉ l := (List.nodup_cons.1 hnd).1
    obtain ⟨h1, h2, h3, h4⟩ := hch
    have hch2 : LChain (upd c.cache y ⟨-1, -1, false⟩) y l :=
      LChain_frame l y (fun x hx => by
        have : x ≠ y := fun e => hyl (e ▸ hx)
        simp [upd, this]) h4
    obtain ⟨c1, e1, e2, e3, e4, e5⟩ := clear_loop_spec l k
      { c with cache := upd c.cache y ⟨-1, -1, false⟩ } y (List.nodup_cons.1 hnd).2
      (fun x hx => hval x (List.mem_cons_of_mem _ hx)) hch2 (by simp at hf; omega)
    refine ⟨c1, ?_, ?_, ?_, e4, e5⟩
    · simp only [List.headD_cons, clear_loop, ne_eq, hy1, not_false_eq_true, if_true]
      rw [h3]
      exact e1
    · intro x hx
      rcases List.mem_cons.1 hx with rfl | hx
      · rw [e3 x hyl]
        simp [upd]
      · exact e2 x hx
    · intro x hx
      have hxy : x ≠ y := fun e => hx (e ▸ List.mem_cons_self _ _)
      rw [e3 x (fun e => hx (List.mem_cons_of_mem _ e))]
      simp [upd, hxy]

/-- Method `clear` empties the list held by the cache. -/
theorem clear_holds (c : LRUCache) (l : List Int) (fuel : Nat) (h : c.Holds l)
    (hf : l.length < fuel) :
    ∃ c1, c.clear fuel = some c1 ∧ c1.Holds [] ∧ c1.cache_size = c.cache_size := by
  obtain ⟨hl, hcnt, hle⟩ := h
  obtain ⟨c1, e1, e2, e3, e4, e5⟩ := clear_loop_spec l fuel { c with counter := 0 } (-1)
    hl.nodup hl.valid hl.chain hf
  rw [← hl.head_eq] at e1
  refine ⟨{ c1 with head := -1, tail := -1 }, ?_, ⟨⟨List.nodup_nil, (fun x hx => by cases hx),
    trivial, rfl, rfl, ?_⟩, ?_, ?_⟩, e5⟩
  · unfold clear
    rw [e1]
  · intro x _
    by_cases hx : x ∈ l
    · exact e2 x hx
    · show (c1.cache x).used = false
      rw [e3 x hx]
      exact hl.unused x hx
  · show c1.counter = _
    rw [e4]; rfl
  · show (0 : Int) ≤ c1.cache_size
    rw [e5]
    show (0 : Int) ≤ c.cache_size
    have : (0 : Int) ≤ l.length := Int.natCast_nonneg _
    omega

theorem iterate_chain (c : LRUCache) : ∀ (l : List Int) (fuel : Nat) (p : Int),
    (∀ x ∈ l, x ≠ -1) → LChain c.cache p l → l.length < fuel →
    c.iterate fuel (l.headD (-1)) = some l
  | [], fuel, p, _, _, hf => by
    obtain ⟨k, rfl⟩ : ∃ k, fuel = k + 1 := ⟨fuel - 1, by simp at hf; omega⟩
    simp [iterate]
  | y :: l, fuel, p, hval, hch, hf => by
    obtain ⟨k, rfl⟩ : ∃ k, fuel = k + 1 := ⟨fuel - 1, by simp at hf; omega⟩
    have hy1 : y ≠ -1 := hval y (by simp)
    have ih := iterate_chain c l k y (fun x hx => hval x (List.mem_cons_of_mem _ hx))
      hch.2.2.2 (by simp at hf; omega)
    simp only [List.headD_cons, iterate, ne_eq, hy1, not_false_eq_true, if_true]
    rw [hch.2.2.1, ih]
    rfl

/-- Iterating `begin()`, `get_next(..)` until `end()` yields the list held by the cache. -/
theorem iterate_holds (c : LRUCache) (l : List Int) (fuel : Nat) (h : c.Holds l)
    (hf : l.length < fuel) : c.iterate fuel c.head = some l := by
  rw [h.links.head_eq]
  exact iterate_chain c l fuel (-1) h.links.valid h.links.chain hf

theorem create_holds (H : Nat) : (create H).Holds [] :=
  ⟨⟨List.nodup_nil, (fun x hx => by cases hx), trivial, rfl, rfl, (fun _ _ => rfl)⟩, rfl,
    by simp [create]⟩

theorem reaches_of_mem (c : LRUCache) (v : Int) : ∀ (l : List Int) (fuel : Nat) (p : Int),
    (∀ x ∈ l, x ≠ -1) → LChain c.cache p l → l.length ≤ fuel → v ∈ l →
    c.reaches fuel (l.headD (-1)) v = true
  | [], _, _, _, _, _, hv => by cases hv
  | y :: l, fuel, p, hval, hch, hf, hv => by
    obtain ⟨k, rfl⟩ : ∃ k, fuel = k + 1 := ⟨fuel - 1, by simp at hf; omega⟩
    have hy1 : y ≠ -1 := hval y (by simp)
    simp only [List.headD_cons, reaches, hy1, if_false]
    by_cases hyv : y = v
    · simp [hyv]
    · rw [if_neg hyv, hch.2.2.1]
      have hv2 : v ∈ l := by
        rcases List.mem_cons.1 hv with e | e
        · exact absurd e.symm hyv
        · exact e
      exact reaches_of_mem c v l k y (fun x hx => hval x (List.mem_cons_of_mem _ hx))
        hch.2.2.2 (by simp at hf; omega) hv2

theorem reaches_imp_mem (c : LRUCache) (v : Int) : ∀ (l : List Int) (fuel : Nat) (p : Int),
    LChain c.cache p l → c.reaches fuel (l.headD (-1)) v = true → v ∈ l
  | _, 0, _, _, h => by simp [reaches] at h
  | [], fuel + 1, _, _, h => by simp [reaches] at h
  | y :: l, fuel + 1, p, hch, h => by
    simp only [List.headD_cons, reaches] at h
    by_cases hy1 : y = -1
    · simp [hy1] at h
    · rw [if_neg hy1] at h
      by_cases hyv : y = v
      · simp [hyv]
      · rw [if_neg hyv, hch.2.2.1] at h
        exact List.mem_cons_of_mem _ (reaches_imp_mem c v l fuel y hch.2.2.2 h)

end LRUCache

theorem lruInsert_length (H : Nat) (v : Int) (l : List Int) (h : l.length ≤ H) (hH : 1 ≤ H)
    (hnd : l.Nodup) : (lruInsert H v l).length ≤ H ∧ v ∈ lruInsert H v l := by
  unfold lruInsert
  split_ifs with h1 h2
  · obtain ⟨a, b, rfl⟩ := List.append_of_mem h1
    have hn := List.nodup_append.1 hnd
    have hva : v ∉ a := fun e => hn.2.2 e (List.mem_cons_self _ _)
    have hvb : v ∉ b := (List.nodup_cons.1 hn.2.1).1
    rw [filter_ne_append hva hvb]
    simp at h ⊢
    omega
  · simp; omega
  · simp; omega
namespace LRUCache

theorem calls_hold (H : Nat) (hH : 1 ≤ H) (fuel : Nat) (hf : H < fuel) :
    ∀ (calls : List LruCall) (c : LRUCache) (l : List Int), c.Holds l → c.cache_size = H →
    (∀ a ∈ calls, a ≠ LruCall.insert (-1)) →
    ∃ c1, LRUCache.calls fuel c calls = some c1 ∧ c1.Holds (lruList H l calls) ∧
      c1.cache_size = H
  | [], c, l, h, hc, _ => ⟨c, rfl, h, hc⟩
  | LruCall.insert v :: rest, c, l, h, hc, hv => by
    have hv1 : v ≠ -1 := fun e => hv (LruCall.insert v) (List.mem_cons_self _ _) (by rw [e])
    obtain ⟨h1, h2⟩ := insert_holds c H l v h hc hH hv1
    obtain ⟨c1, e1, e2, e3⟩ := calls_hold H hH fuel hf rest (c.insert v) _ h1 h2
      (fun a ha => hv a (List.mem_cons_of_mem _ ha))
    exact ⟨c1, by simpa [LRUCache.calls, LRUCache.call] using e1, e2, e3⟩
  | LruCall.clear :: rest, c, l, h, hc, hv => by
    have hlen : l.length < fuel := by
      have := h.length_le
      rw [hc] at this
      have : l.length ≤ H := by exact_mod_cast this
      omega
    obtain ⟨c0, h0, h1, h2⟩ := clear_holds c l fuel h hlen
    obtain ⟨c1, e1, e2, e3⟩ := calls_hold H hH fuel hf rest c0 [] h1 (h2.trans hc)
      (fun a ha => hv a (List.mem_cons_of_mem _ ha))
    exact ⟨c1, by simpa [LRUCache.calls, LRUCache.call, h0] using e1, e2, e3⟩

end LRUCache

theorem mem_lruInsert_twice (H : Nat) (hH : 2 ≤ H) (p w : Int) (l : List Int) :
    p ∈ lruInsert H w (lruInsert H p l) ∧ w ∈ lruInsert H w (lruInsert H p l) := by
  have hp : ∃ t, lruInsert H p l = p :: t := by
    unfold lruInsert
    split_ifs <;> exact ⟨_, rfl⟩
  obtain ⟨t, ht⟩ := hp
  rw [ht]
  unfold lruInsert
  by_cases hpw : p = w
  · subst hpw
    simp
  · split_ifs with h1 h2
    · simp [hpw]
    · cases t with
      | nil => simp at h2; omega
      | cons y t => simp [List.dropLast]
    · simp

theorem not_mem_lruInsert (H : Nat) (v w : Int) (l : List Int) (hv : v ∉ l) (hvw : v ≠ w) :
    v ∉ lruInsert H w l := by
  unfold lruInsert
  split_ifs
  · simp only [List.mem_cons, List.mem_filter, not_or, not_and]
    exact ⟨hvw, fun h => absurd h hv⟩
  · simp only [List.mem_cons, not_or]
    exact ⟨hvw, fun h => hv (List.mem_of_mem_dropLast h)⟩
  · simp only [List.mem_cons, not_or]
    exact ⟨hvw, hv⟩

namespace Solution

theorem insert_vertex_cache (I : Instance) (s : Solution) (ra : Bool) (r : Nat) (wh v : Int) :
    (insert_vertex_before I s ra r wh v).cache =
      (s.cache.insert (if v = 0 then (s.customers_list wh).prev else s.get_prev_vertex r wh)
        ).insert wh := by
  by_cases hv : v = 0
  · simp [insert_vertex_before, hv]
  · simp [insert_vertex_before, hv, get_prev_vertex, get_last_customer]

end Solution
/-! ## The list of routes and `release_route` -/

theorem RChain_frame {rl rl2 : Nat → RouteNode} : ∀ (L : List Nat) (p : Nat),
    (∀ r ∈ L, (rl2 r).next = (rl r).next ∧ (rl2 r).prev = (rl r).prev) →
    RChain rl p L → RChain rl2 p L
  | [], _, _, _ => trivial
  | x :: rest, p, h, hc => by
    obtain ⟨h1, h2, h3⟩ := hc
    have hx := h x (List.mem_cons_self _ _)
    exact ⟨by rw [hx.2]; exact h1, by rw [hx.1]; exact h2,
      RChain_frame rest x (fun y hy => h y (List.mem_cons_of_mem _ hy)) h3⟩

theorem RChain_mid {rl : Nat → RouteNode} {S : Nat} {b : List Nat} : ∀ (a : List Nat) (p : Nat),
    RChain rl p (a ++ S :: b) →
    (rl S).prev = a.getLastD p ∧ (rl S).next = b.headD 0 ∧ RChain rl S b
  | [], _, hc => ⟨hc.1, hc.2.1, hc.2.2⟩
  | x :: a, _, hc => by
    rw [List.getLastD_cons]
    exact RChain_mid a x hc.2.2

/-- Unlinking `S` from a chain: if `rl2` is `rl` with the `next` of the route before `S` and
the `prev` of the route after `S` redirected, the chain loses `S`. -/
theorem RChain_unlink {rl rl2 : Nat → RouteNode} {S : Nat} {b : List Nat}
    (h2 : ∀ r, r ≠ S →
      (rl2 r).next = (if r = (rl S).prev then (rl S).next else (rl r).next) ∧
      (rl2 r).prev = (if r = (rl S).next then (rl S).prev else (rl r).prev)) :
    ∀ (a : List Nat) (p : Nat), (a ++ S :: b).Nodup → (∀ r ∈ a ++ S :: b, r ≠ 0) →
    p ∉ a ++ S :: b → RChain rl p (a ++ S :: b) → RChain rl2 p (a ++ b)
  | [], p, hnd, hval, hp, hc => by
    obtain ⟨hq, hn, hb⟩ := @RChain_mid rl S b [] p hc
    simp only [List.getLastD_nil] at hq
    simp only [List.nil_append] at hnd hval hp ⊢
    have hSb : S ∉ b := (List.nodup_cons.1 hnd).1
    have hndb : b.Nodup := (List.nodup_cons.1 hnd).2
    cases b with
    | nil => trivial
    | cons y b =>
      have hyS : y ≠ S := fun h => hSb (h ▸ List.mem_cons_self _ _)
      have hyp : y ≠ p := fun h => hp (h ▸ by simp)
      have hyb : y ∉ b := (List.nodup_cons.1 hndb).1
      simp only [List.headD_cons] at hn
      obtain ⟨e1, e2⟩ := h2 y hyS
      rw [hq, hn] at e1 e2
      rw [if_neg hyp] at e1
      rw [if_pos rfl] at e2
      obtain ⟨h1, h3, h4⟩ := hb
      refine ⟨e2, by rw [e1]; exact h3, ?_⟩
      refine RChain_frame b y (fun x hx => ?_) h4
      have hxS : x ≠ S := fun h => hSb (h ▸ List.mem_cons_of_mem _ hx)
      have hxp : x ≠ p := fun h => hp (h ▸ by simp [hx])
      have hxy : x ≠ y := fun h => hyb (h ▸ hx)
      obtain ⟨f1, f2⟩ := h2 x hxS
      rw [hq, hn] at f1 f2
      rw [if_neg hxp] at f1
      rw [if_neg hxy] at f2
      exact ⟨f1, f2⟩
  | x :: a, p, hnd, hval, hp, hc => by
    obtain ⟨h1, h3, h4⟩ := hc
    have hxr : x ∉ a ++ S :: b := (List.nodup_cons.1 hnd).1
    have hndr : (a ++ S :: b).Nodup := (List.nodup_cons.1 hnd).2
    have ih := RChain_unlink h2 a x hndr
      (fun y hy => hval y (List.mem_cons_of_mem _ hy)) hxr h4
    obtain ⟨hq, hn, hb⟩ := @RChain_mid rl S b a x h4
    have hx0 : x ≠ 0 := hval x (by simp)
    have hxS : x ≠ S := fun h => hxr (h ▸ by simp)
    have hxn : x ≠ (rl S).next := by
      rw [hn]
      cases b with
      | nil => exact hx0
      | cons y b => exact fun e => hxr (e ▸ by simp)
    obtain ⟨e1, e2⟩ := h2 x hxS
    rw [if_neg hxn] at e2
    refine ⟨by rw [e2]; exact h1, ?_, ih⟩
    rw [e1, hq, hn]
    cases a with
    | nil =>
      simp only [List.getLastD_nil, if_true, List.nil_append]
      rfl
    | cons z a =>
      have hxq : x ≠ (z :: a).getLastD x := by
        rw [List.getLastD_cons]
        exact fun e => hxr (e ▸ List.mem_append_left _ (List.getLastD_mem_cons a z))
      rw [if_neg hxq, h3]
      rfl

namespace Solution

theorem release_route_links (s : Solution) (S r : Nat) (hr : r ≠ S) :
    ((s.release_route S).routes_list r).next =
      (if r = (s.routes_list S).prev then (s.routes_list S).next else (s.routes_list r).next) ∧
    ((s.release_route S).routes_list r).prev =
      (if r = (s.routes_list S).next then (s.routes_list S).prev else (s.routes_list r).prev) := by
  simp only [release_route, reset_route]
  refine ⟨?_, ?_⟩
  · simp [hr]
  · simp [hr]

theorem release_route_first (s : Solution) (S : Nat) :
    (s.release_route S).depot_node.first_route =
      (if s.depot_node.first_route = S then (s.routes_list S).next
       else s.depot_node.first_route) := by
  simp only [release_route, reset_route]
  simp
  split_ifs <;> simp_all

/-- Method `release_route` takes the route out of the linked list of routes. -/
theorem release_route_list (s : Solution) (S : Nat) (a b : List Nat)
    (h : s.RouteList (a ++ S :: b)) : (s.release_route S).RouteList (a ++ b) := by
  obtain ⟨hnd, hval, hch, hfirst⟩ := h
  have h0 : (0 : Nat) ∉ a ++ S :: b := fun e => hval 0 e rfl
  have hn := List.nodup_append.1 hnd
  obtain ⟨hq, hnx, _⟩ := @RChain_mid s.routes_list S b a 0 hch
  refine ⟨?_, ?_, RChain_unlink (fun r hr => release_route_links s S r hr) a 0 hnd hval h0 hch, ?_⟩
  · refine List.nodup_append.2 ⟨hn.1, (List.nodup_cons.1 hn.2.1).2, ?_⟩
    intro x hx hxb
    exact hn.2.2 hx (List.mem_cons_of_mem _ hxb)
  · intro r hr
    refine hval r ?_
    simp only [List.mem_append, List.mem_cons] at hr ⊢
    tauto
  · rw [release_route_first, hfirst, hnx]
    cases a with
    | nil => simp
    | cons x a =>
      have hxS : x ≠ S := fun e => hn.2.2 (List.mem_cons_self _ _) (e ▸ List.mem_cons_self _ _)
      simp [hxS]

theorem routes_from_chain (s : Solution) : ∀ (L : List Nat) (fuel : Nat) (p : Nat),
    (∀ r ∈ L, r ≠ 0) → RChain s.routes_list p L → L.length < fuel →
    s.routes_from fuel (L.headD 0) = some L
  | [], fuel, p, _, _, hf => by
    obtain ⟨k, rfl⟩ : ∃ k, fuel = k + 1 := ⟨fuel - 1, by simp at hf; omega⟩
    simp [routes_from, get_end_route]
  | y :: L, fuel, p, hval, hch, hf => by
    obtain ⟨k, rfl⟩ : ∃ k, fuel = k + 1 := ⟨fuel - 1, by simp at hf; omega⟩
    have hy1 : y ≠ 0 := hval y (by simp)
    have ih := routes_from_chain s L k y (fun x hx => hval x (List.mem_cons_of_mem _ hx))
      hch.2.2 (by simp at hf; omega)
    simp only [List.headD_cons, routes_from, get_end_route, ne_eq, hy1, not_false_eq_true,
      if_true, get_next_route]
    rw [hch.2.1, ih]
    rfl

/-- The loop over the routes visits the linked list of routes. -/
theorem routes_from_list (s : Solution) (L : List Nat) (fuel : Nat) (h : s.RouteList L)
    (hf : L.length < fuel) : s.routes_from fuel s.get_first_route = some L := by
  unfold get_first_route
  rw [h.first_eq]
  exact routes_from_chain s L fuel 0 h.valid h.chain hf

theorem append_loop_routes (R : Nat) : ∀ (fuel : Nat) (s s8 : Solution) (x : Int),
    append_loop R fuel s x = some s8 →
    s8.routes_list = s.routes_list ∧ s8.depot_node = s.depot_node
  | 0, _, _, _, h => by simp [append_loop] at h
  | fuel + 1, s, s8, x, h => by
    simp only [append_loop] at h
    by_cases hx : x = 0
    · simp only [hx, ne_eq, not_true_eq_false, if_false] at h
      cases h
      exact ⟨rfl, rfl⟩
    · simp only [ne_eq, hx, not_false_eq_true, if_true] at h
      obtain ⟨e1, e2⟩ := append_loop_routes R fuel _ s8 _ h
      exact ⟨by rw [e1]; simp, by rw [e2]; simp⟩

/-- Method `append_route` takes the appended route out of the linked list of routes. -/
theorem append_route_list (I : Instance) (s s9 : Solution) (R S : Nat) (fuel : Nat)
    (a b : List Nat) (h : s.RouteList (a ++ S :: b))
    (e : append_route I s R S fuel = some s9) : s9.RouteList (a ++ b) := by
  rw [append_route_eq] at e
  cases h8 : append_loop R fuel (s.append_link I R S) (s.routes_list S).first_customer with
  | none => rw [h8] at e; cases e
  | some s8 =>
    rw [h8] at e
    simp only [Option.map_some', Option.some.injEq] at e
    obtain ⟨e1, e2⟩ := append_loop_routes R fuel _ s8 _ h8
    have hl : s8.RouteList (a ++ S :: b) := by
      refine ⟨h.nodup, h.valid, RChain_frame _ 0 (fun r _ => ?_) h.chain, ?_⟩
      · rw [e1]
        simp [append_link]
      · rw [e2, ← h.first_eq]
        simp [append_link]
    have hr := release_route_list s8 S a b hl
    have e3 : s8.remove_route false S = s8.release_route S := by
      simp [remove_route, record]
    rw [← e, e3]
    exact ⟨hr.nodup, hr.valid, RChain_frame _ 0 (fun r _ => by simp) hr.chain,
      by simpa using hr.first_eq⟩

end Solution
/-! ## Cumulative loads: what the mutations leave alone -/

namespace Solution

theorem build_cumFrame (I : Instance) (s : Solution) (ra : Bool) (c : Int) :
    CumFrame s (build_one_customer_route I s ra c).2 [(build_one_customer_route I s ra c).1] := by
  refine ⟨fun u => ?_, fun q hq => ?_, fun q hq => ?_⟩
  · simp [build_one_customer_route, request_route]
  · have hq2 : q ≠ s.routes_pool.get.1 := by
      simpa [build_one_customer_route, request_route] using hq
    simp [build_one_customer_route, request_route, hq2]
  · have hq2 : q = s.routes_pool.get.1 := by
      simpa [build_one_customer_route, request_route] using hq
    simp [build_one_customer_route, request_route, hq2]

theorem remove_vertex_cumFrame (I : Instance) (s : Solution) (ra : Bool) (r : Nat) (v : Int) :
    CumFrame s (remove_vertex I s ra r v).1 [r] := by
  refine ⟨fun u => ?_, fun q hq => ?_, fun q hq => ?_⟩
  · by_cases hv : v = 0
    · simp [remove_vertex, hv]
    · simp only [remove_vertex, hv, if_false, reset_vertex]
      split_ifs <;> simp
  · have hq2 : q ≠ r := by simpa using hq
    by_cases hv : v = 0
    · simp [remove_vertex, hv, hq2]
    · simp only [remove_vertex, hv, if_false, reset_vertex]
      split_ifs <;> simp [hq2]
  · have hq2 : q = r := by simpa using hq
    by_cases hv : v = 0
    · simp [remove_vertex, hv, hq2]
    · simp only [remove_vertex, hv, if_false, reset_vertex]
      split_ifs <;> simp [hq2]

theorem insert_vertex_cumFrame (I : Instance) (s : Solution) (ra : Bool) (r : Nat)
    (w v : Int) : CumFrame s (insert_vertex_before I s ra r w v) [r] := by
  refine ⟨fun u => ?_, fun q hq => ?_, fun q hq => ?_⟩
  · by_cases hv : v = 0
    · simp [insert_vertex_before, hv]
    · simp [insert_vertex_before, hv]
  · have hq2 : q ≠ r := by simpa using hq
    by_cases hv : v = 0
    · simp [insert_vertex_before, hv, hq2]
    · simp [insert_vertex_before, hv, hq2]
  · have hq2 : q = r := by simpa using hq
    simp [insert_vertex_before, hq2]

theorem remove_route_cumFrame (s : Solution) (ra : Bool) (r : Nat) :
    CumFrame s (s.remove_route ra r) [r] := by
  refine ⟨fun u => ?_, fun q hq => ?_, fun q hq => ?_⟩
  · simp [remove_route, release_route, reset_route]
  · have hq2 : q ≠ r := by simpa using hq
    simp [remove_route, release_route, reset_route, hq2]
  · have hq2 : q = r := by simpa using hq
    simp [remove_route, release_route, reset_route, hq2]

theorem flag_cumFrame (s : Solution) (r : Nat) :
    CumFrame s (s.set_route_needs_cumulative_load_update r true) [r] := by
  refine ⟨fun u => ⟨rfl, rfl⟩, fun q hq => ?_, fun q hq => ?_⟩
  · have hq2 : q ≠ r := by simpa using hq
    simp [hq2]
  · have hq2 : q = r := by simpa using hq
    simp [hq2]

end Solution
namespace Solution

theorem reverse_step_cum (s : Solution) (r : Nat) (curr : Int) :
    (∀ u, ((s.reverse_step r curr).1.customers_list u).load_before =
        (s.customers_list u).load_before ∧
      ((s.reverse_step r curr).1.customers_list u).load_after =
        (s.customers_list u).load_after) ∧
    (∀ q, ((s.reverse_step r curr).1.routes_list q).needs_cumulative_load_update =
      (s.routes_list q).needs_cumulative_load_update) := by
  refine ⟨fun u => ?_, fun q => ?_⟩
  · simp only [reverse_step]
    split_ifs <;> simp
  · simp only [reverse_step]
    split_ifs <;> simp

theorem reverse_loop_cum (r : Nat) (stop : Int) : ∀ (fuel : Nat) (s s2 : Solution) (curr : Int),
    reverse_loop r stop fuel s curr = some s2 →
    (∀ u, (s2.customers_list u).load_before = (s.customers_list u).load_before ∧
      (s2.customers_list u).load_after = (s.customers_list u).load_after) ∧
    (∀ q, (s2.routes_list q).needs_cumulative_load_update =
      (s.routes_list q).needs_cumulative_load_update)
  | 0, _, _, _, h => by simp [reverse_loop] at h
  | fuel + 1, s, s2, curr, h => by
    simp only [reverse_loop] at h
    obtain ⟨a1, a2⟩ := reverse_step_cum s r curr
    by_cases hc : (s.reverse_step r curr).2 = stop
    · simp only [hc, ne_eq, not_true_eq_false, if_false, Option.some.injEq] at h
      rw [← h]
      exact ⟨a1, a2⟩
    · simp only [ne_eq, hc, not_false_eq_true, if_true] at h
      obtain ⟨b1, b2⟩ := reverse_loop_cum r stop fuel _ s2 _ h
      exact ⟨fun u => ⟨(b1 u).1.trans (a1 u).1, (b1 u).2.trans (a1 u).2⟩,
        fun q => (b2 q).trans (a2 q)⟩

theorem reverse_cumFrame (I : Instance) (s s2 : Solution) (ra : Bool) (r : Nat) (a b : Int)
    (fuel : Nat) (h : reverse_route_path I s ra r a b fuel = some s2) : CumFrame s s2 [r] := by
  unfold reverse_route_path at h
  dsimp only at h
  cases hl : reverse_loop r ((s.record ra (Action.reverse_route_path r a b)
      (Action.reverse_route_path r b a)).get_next_vertex r b) fuel
      (((s.record ra (Action.reverse_route_path r a b)
        (Action.reverse_route_path r b a)).cache_insert
          ((s.record ra (Action.reverse_route_path r a b)
            (Action.reverse_route_path r b a)).get_prev_vertex r a)).cache_insert
          ((s.record ra (Action.reverse_route_path r a b)
            (Action.reverse_route_path r b a)).get_next_vertex r b)) a with
  | none => rw [hl] at h; cases h
  | some s3 =>
    rw [hl] at h
    simp only [Option.some.injEq] at h
    obtain ⟨b1, b2⟩ := reverse_loop_cum r _ fuel _ s3 _ hl
    rw [← h]
    refine ⟨fun u => ?_, fun q hq => ?_, fun q hq => ?_⟩
    · have := b1 u
      simp only [cache_insert_customers_list, record_customers_list] at this
      split_ifs <;> simp [this]
    · have hq2 : q ≠ r := by simpa using hq
      have := b2 q
      simp only [cache_insert_routes_list, record_routes_list] at this
      split_ifs <;> simp [this, hq2]
    · have hq2 : q = r := by simpa using hq
      simp [hq2]

theorem append_loop_cum (R : Nat) : ∀ (fuel : Nat) (s s8 : Solution) (x : Int),
    append_loop R fuel s x = some s8 →
    ∀ u, (s8.customers_list u).load_before = (s.customers_list u).load_before ∧
      (s8.customers_list u).load_after = (s.customers_list u).load_after
  | 0, _, _, _, h => by simp [append_loop] at h
  | fuel + 1, s, s8, x, h => by
    simp only [append_loop] at h
    by_cases hx : x = 0
    · simp only [hx, ne_eq, not_true_eq_false, if_false] at h
      cases h
      exact fun u => ⟨rfl, rfl⟩
    · simp only [ne_eq, hx, not_false_eq_true, if_true] at h
      have ih := append_loop_cum R fuel _ s8 _ h
      intro u
      obtain ⟨e1, e2⟩ := ih u
      exact ⟨by rw [e1]; simp, by rw [e2]; simp⟩

theorem append_cumFrame (I : Instance) (s s9 : Solution) (R S : Nat) (fuel : Nat)
    (e : append_route I s R S fuel = some s9) : CumFrame s s9 [R, S] := by
  rw [append_route_eq] at e
  cases h8 : append_loop R fuel (s.append_link I R S) (s.routes_list S).first_customer with
  | none => rw [h8] at e; cases e
  | some s8 =>
    rw [h8] at e
    simp only [Option.map_some', Option.some.injEq] at e
    obtain ⟨e1, e2⟩ := append_loop_routes R fuel _ s8 _ h8
    have e3 := append_loop_cum R fuel _ s8 _ h8
    obtain ⟨f1, f2, f3⟩ := remove_route_cumFrame s8 false S
    rw [← e]
    refine ⟨fun u => ?_, fun q hq => ?_, fun q hq => ?_⟩
    · obtain ⟨g1, g2⟩ := f1 u
      obtain ⟨k1, k2⟩ := e3 u
      simp only [set_route_needs_cumulative_load_update_customers_list]
      rw [g1, g2, k1, k2]
      simp [append_link]
    · have hq2 : q ≠ R ∧ q ≠ S := by simpa using hq
      simp only [set_route_needs_cumulative_load_update_r_needs_cumulative_load_update,
        if_neg hq2.1]
      rw [f2 q (by simpa using hq2.2), e1]
      simp [append_link]
    · by_cases hqR : q = R
      · simp [hqR]
      · have hqS : q = S := by
          simp only [List.mem_cons, List.mem_singleton, List.not_mem_nil, or_false] at hq
          exact hq.resolve_left hqR
        simp only [set_route_needs_cumulative_load_update_r_needs_cumulative_load_update,
          if_neg hqR]
        exact f3 q (by simp [hqS])

end Solution
/-! ## Cumulative loads: the update and the invariant -/

theorem CumFresh_congr {I : Instance} {cl cl2 : Int → CustomerNode} : ∀ (t : List Int)
    (b a : Int), (∀ u ∈ t, (cl2 u).load_before = (cl u).load_before ∧
      (cl2 u).load_after = (cl u).load_after) → CumFresh I cl b a t → CumFresh I cl2 b a t
  | [], _, _, _, _ => trivial
  | c :: rest, b, a, h, hc => by
    obtain ⟨h1, h2, h3⟩ := hc
    obtain ⟨e1, e2⟩ := h c (List.mem_cons_self _ _)
    exact ⟨by rw [e1]; exact h1, by rw [e2]; exact h2,
      CumFresh_congr rest _ _ (fun u hu => h u (List.mem_cons_of_mem _ hu)) h3⟩

/-- What up-to-date cumulative loads say about a customer in the middle of the route. -/
theorem CumFresh_mid {I : Instance} {cl : Int → CustomerNode} {c : Int} {q : List Int} :
    ∀ (p : List Int) (b a : Int), CumFresh I cl b a (p ++ c :: q) →
    (cl c).load_before = b + ((p ++ [c]).map I.demand).sum ∧
    (cl c).load_after = a - (p.map I.demand).sum
  | [], b, a, h => by
    obtain ⟨h1, h2, _⟩ := h
    simp [h1, h2]
  | x :: p, b, a, h => by
    obtain ⟨_, _, h3⟩ := h
    obtain ⟨e1, e2⟩ := CumFresh_mid p _ _ h3
    rw [e1, e2]
    simp only [List.cons_append, List.map_cons, List.sum_cons]
    constructor <;> ring

theorem Rep_of_agree {I : Instance} {s s2 : Solution} {A : Nat → List Int} (hR : Rep I s A)
    (hc : ∀ u, CustomerNode.agree (s2.customers_list u) (s.customers_list u))
    (hr : ∀ r, RouteNode.agree (s2.routes_list r) (s.routes_list r))
    (hpool : s2.routes_pool = s.routes_pool)
    (hmax : s2.max_number_routes = s.max_number_routes) : Rep I s2 A :=
  { routes := fun r => RouteRep_frame (hR.routes r) (hr r) (fun u _ _ => hc u)
      (fun u hu hnu hp => by
        by_contra h0
        rw [(hc u).2.2.1] at hp
        exact hnu (((hR.routes r).mem_iff u hu).2 ⟨hp, h0⟩))
    bound := fun r h => by rw [hmax]; exact hR.bound r h
    unserved := fun v h1 h2 h3 => by
      obtain ⟨c1, c2, c3, _⟩ := hc v
      rw [c3] at h3
      rw [c1, c2]
      exact hR.unserved v h1 h2 h3
    pool_le := by rw [hpool]; exact hR.pool_le
    pool_absent := fun i h1 h2 => by
      rw [hpool] at h1 h2 ⊢
      rw [hmax]
      exact hR.pool_absent i h1 h2
    pool_inj := fun i j h1 h2 h3 h4 h5 => by
      rw [hpool] at h1 h2 h3 h4 h5
      exact hR.pool_inj i j h1 h2 h3 h4 h5
    pool_nonneg := by rw [hpool]; exact hR.pool_nonneg
    pool_cap := by rw [hpool, hmax]; exact hR.pool_cap }

theorem CumOK_frame {I : Instance} {s s2 : Solution} {A B : Nat → List Int} {rs : List Nat}
    (h : CumOK I s A) (hf : CumFrame s s2 rs) (hB : ∀ q, q ∉ rs → B q = A q) :
    CumOK I s2 B := by
  intro r t hr hflag
  obtain ⟨f1, f2, f3⟩ := hf
  have hrs : r ∉ rs := by
    intro hin
    rw [f3 r hin] at hflag
    cases hflag
  rw [hB r hrs] at hr
  rw [f2 r hrs] at hflag
  exact CumFresh_congr t _ _ (fun u _ => f1 u) (h r t hr hflag)

theorem CumOK_rotate {I : Instance} {s : Solution} {A : Nat → List Int} (h : CumOK I s A)
    {r : Nat} {l : List Int} (hl : A r ~r l) : CumOK I s (upd A r l) := by
  intro q t hq hflag
  by_cases hqr : q = r
  · subst hqr
    rw [upd_same] at hq
    exact h q t (hl.trans hq) hflag
  · rw [upd_other _ _ _ _ hqr] at hq
    exact h q t hq hflag

namespace Solution

theorem cumulative_loop_spec (I : Instance) : ∀ (l : List Int) (fuel : Nat) (s : Solution)
    (prev : Int), NextChain (fun u => (s.customers_list u).next) prev l 0 →
    (prev :: l).Nodup → (∀ u ∈ l, u ≠ 0) → l.length < fuel →
    ∃ s2, cumulative_loop I fuel s prev (s.customers_list prev).next = some s2 ∧
      CumFresh I s2.customers_list (s.customers_list prev).load_before
        ((s.customers_list prev).load_after - I.demand prev) l ∧
      (∀ u, u ∉ l → s2.customers_list u = s.customers_list u) ∧
      (∀ u, CustomerNode.agree (s2.customers_list u) (s.customers_list u)) ∧
      s2.routes_list = s.routes_list ∧ s2.routes_pool = s.routes_pool ∧
      s2.max_number_routes = s.max_number_routes
  | [], fuel, s, prev, hch, _, _, hf => by
    obtain ⟨k, rfl⟩ : ∃ k, fuel = k + 1 := ⟨fuel - 1, by simp at hf; omega⟩
    simp only [NextChain] at hch
    refine ⟨s, by simp [cumulative_loop, hch], trivial, fun u _ => rfl,
      fun u => ⟨rfl, rfl, rfl, rfl⟩, rfl, rfl, rfl⟩
  | y :: l, fuel, s, prev, hch, hnd, h0, hf => by
    obtain ⟨k, rfl⟩ : ∃ k, fuel = k + 1 := ⟨fuel - 1, by simp at hf; omega⟩
    simp only [NextChain] at hch
    obtain ⟨hn, hch2⟩ := hch
    have hy0 : y ≠ 0 := h0 y (List.mem_cons_self _ _)
    have hpy : prev ≠ y := fun e => (List.nodup_cons.1 hnd).1 (e ▸ List.mem_cons_self _ _)
    have hnd2 : (y :: l).Nodup := (List.nodup_cons.1 hnd).2
    have hyl : y ∉ l := (List.nodup_cons.1 hnd2).1
    obtain ⟨s3, e, c1, c2, c3, c4, c5, c6⟩ := cumulative_loop_spec I l k
      ((s.set_customer_load_before y ((s.customers_list prev).load_before + I.demand y)
        ).set_customer_load_after y
          (((s.set_customer_load_before y ((s.customers_list prev).load_before + I.demand y)
            ).customers_list prev).load_after - I.demand prev)) y
      (NextChain_congr y l 0 (fun u _ => by simp) hch2) hnd2
      (fun u hu => h0 u (List.mem_cons_of_mem _ hu)) (by simp at hf; omega)
    refine ⟨s3, ?_, ?_, ?_, ?_, ?_, ?_, ?_⟩
    · rw [hn]
      simp only [cumulative_loop, ne_eq, hy0, not_false_eq_true, if_true]
      exact e
    · have hy3 := c2 y hyl
      refine ⟨?_, ?_, ?_⟩
      · rw [hy3]; simp
      · rw [hy3]; simp [hpy]
      · simpa [hpy] using c1
    · intro u hu
      have hu1 : u ≠ y := fun e => hu (e ▸ List.mem_cons_self _ _)
      rw [c2 u (fun e => hu (List.mem_cons_of_mem _ e))]
      simp [set_customer_load_after, set_customer_load_before, upd, hu1]
    · intro u
      obtain ⟨a1, a2, a3, a4⟩ := c3 u
      exact ⟨by rw [a1]; simp, by rw [a2]; simp, by rw [a3]; simp, by rw [a4]; simp⟩
    · rw [c4]; rfl
    · rw [c5]; rfl
    · rw [c6]; rfl

end Solution
namespace Solution

theorem update_cumulative_spec {I : Instance} {s : Solution} {A : Nat → List Int}
    (hR : Rep I s A) {r : Nat} {t : List Int} (hA : A r ~r (0 :: t)) (ht : t ≠ [])
    {fuel : Nat} (hf : I.vertices_num < fuel) :
    ∃ s2, update_cumulative_route_loads I s r fuel = some s2 ∧
      CumFresh I s2.customers_list 0 ((t.map I.demand).sum) t ∧
      (∀ u, u ∉ t → s2.customers_list u = s.customers_list u) ∧
      (∀ u, CustomerNode.agree (s2.customers_list u) (s.customers_list u)) ∧
      s2.routes_list = s.routes_list ∧ s2.routes_pool = s.routes_pool ∧
      s2.max_number_routes = s.max_number_routes := by
  have rr := RouteRep_isRotated hA (hR.routes r)
  obtain ⟨h0, _, hch⟩ := chain_of_routeRep rr
  obtain ⟨x, t2, rfl⟩ : ∃ x t2, t = x :: t2 := by
    cases t with
    | nil => exact absurd rfl ht
    | cons x t2 => exact ⟨x, t2, rfl⟩
  obtain ⟨hfirst, hchain⟩ := hch x t2 rfl
  have hload : (s.routes_list r).load = ((x :: t2).map I.demand).sum := by
    rw [rr.load (by simp)]
    exact (loadOf_depot_cons I h0).1
  have hlen : t2.length < fuel := by
    have h1 := length_le_of_range rr.nodup rr.range
    simp only [List.length_cons] at h1
    omega
  obtain ⟨s3, e, c1, c2, c3, c4, c5, c6⟩ := cumulative_loop_spec I t2 fuel
    ((s.set_customer_load_before x (I.demand x)).set_customer_load_after x
      ((s.set_customer_load_before x (I.demand x)).routes_list r).load) x
    (NextChain_congr x t2 0 (fun u _ => by simp) hchain) (List.nodup_cons.1 rr.nodup).2
    (fun u hu => h0 u (List.mem_cons_of_mem _ hu)) hlen
  have hx2 : x ∉ t2 := (List.nodup_cons.1 (List.nodup_cons.1 rr.nodup).2).1
  refine ⟨s3, ?_, ?_, ?_, ?_, ?_, ?_, ?_⟩
  · unfold update_cumulative_route_loads
    simp only [hfirst]
    exact e
  · have hx3 := c2 x hx2
    refine ⟨?_, ?_, ?_⟩
    · rw [hx3]; simp
    · rw [hx3]; simp [hload]
    · simpa [hload] using c1
  · intro u hu
    have hu1 : u ≠ x := fun e => hu (e ▸ List.mem_cons_self _ _)
    rw [c2 u (fun e => hu (List.mem_cons_of_mem _ e))]
    simp [set_customer_load_after, set_customer_load_before, upd, hu1]
  · intro u
    obtain ⟨a1, a2, a3, a4⟩ := c3 u
    exact ⟨by rw [a1]; simp, by rw [a2]; simp, by rw [a3]; simp, by rw [a4]; simp⟩
  · rw [c4]; rfl
  · rw [c5]; rfl
  · rw [c6]; rfl

/-- The common beginning of the two getters: it returns, leaves the solution represented
by the same cycles, and leaves the cumulative loads of the route of the customer up to
date, with the flag of the route cleared. -/
theorem refresh_spec {I : Instance} {s : Solution} {A : Nat → List Int}
    (hR : Rep I s A) (hC : CumOK I s A) {r : Nat} {t : List Int} (hA : A r ~r (0 :: t))
    {c : Int} (hc : c ∈ t) {fuel : Nat} (hf : I.vertices_num < fuel) :
    ∃ s2, refresh_cumulative_loads I s c fuel = some s2 ∧ Rep I s2 A ∧ CumOK I s2 A ∧
      CumFresh I s2.customers_list 0 ((t.map I.demand).sum) t ∧
      (s2.routes_list r).needs_cumulative_load_update = false := by
  have rr := RouteRep_isRotated hA (hR.routes r)
  obtain ⟨h0, _, _⟩ := chain_of_routeRep rr
  have hc0 : c ≠ 0 := h0 c hc
  have hptr : (s.customers_list c).route_ptr = r :=
    ((rr.mem_iff c hc0).1 (List.mem_cons_of_mem _ hc)).1
  have ht : t ≠ [] := fun e => by rw [e] at hc; cases hc
  unfold refresh_cumulative_loads
  simp only [hptr]
  by_cases hflag : (s.routes_list r).needs_cumulative_load_update = true
  · rw [if_pos hflag]
    obtain ⟨s1, e1, f1, f2, f3, f4, f5, f6⟩ := update_cumulative_spec hR hA ht hf
    rw [e1]
    refine ⟨s1.set_route_needs_cumulative_load_update r false, rfl, ?_, ?_, f1, by simp⟩
    · refine Rep_of_agree hR (fun u => f3 u) (fun q => ?_) f5 f6
      unfold RouteNode.agree
      simp [f4]
    · intro q t2 hq hflag2
      by_cases hqr : q = r
      · subst hqr
        have ht2 : t2 ≠ [] := by
          rintro rfl
          have := (hA.symm.trans hq).perm.length_eq
          simp only [List.length_cons, List.length_nil] at this
          exact ht (List.length_eq_zero.1 (by omega))
        obtain ⟨s1b, e1b, g1, _⟩ := update_cumulative_spec hR hq ht2 hf
        have : s1b = s1 := Option.some.inj (e1b.symm.trans e1)
        rw [this] at g1
        exact g1
      · have hflag3 : (s.routes_list q).needs_cumulative_load_update = false := by
          simpa [f4, hqr] using hflag2
        refine CumFresh_congr t2 _ _ (fun u hu => ?_) (hC q t2 hq hflag3)
        have rq := RouteRep_isRotated hq (hR.routes q)
        have hu0 : u ≠ 0 := (chain_of_routeRep rq).1 u hu
        have huq : u ∈ A q := hq.mem_iff.2 (List.mem_cons_of_mem _ hu)
        have hut : u ∉ t := fun e =>
          hR.not_mem_of_ne (Ne.symm hqr) hu0 huq (hA.mem_iff.2 (List.mem_cons_of_mem _ e))
        show (s1.customers_list u).load_before = _ ∧ (s1.customers_list u).load_after = _
        rw [f2 u hut]
        exact ⟨rfl, rfl⟩
  · have hflag2 : (s.routes_list r).needs_cumulative_load_update = false := by
      simpa using hflag
    rw [if_neg hflag]
    exact ⟨s, rfl, hR, hC, hC r t hA hflag2, hflag2⟩

end Solution

/-- Every solution reached by mutations is represented by its cycles, and no route of it
has its flag cleared while its cumulative loads are stale. -/
theorem Mutated.inv {I : Instance} (hsym : CostSym I) {fuel : Nat} (hf : I.vertices_num < fuel)
    {s : Solution} {A : Nat → List Int} (h : Mutated I fuel s A) : Rep I s A ∧ CumOK I s A := by
  induction h with
  | fresh h =>
    refine ⟨fresh_rep I h, fun r t hr _ => ?_⟩
    exact absurd (List.isRotated_nil_iff'.1 hr) (by simp)
  | rotate r l _ hl ih => exact ⟨Rep_isRotated ih.1 hl, CumOK_rotate ih.2 hl⟩
  | build ra c _ h1 h2 h3 h4 ih =>
    exact ⟨build_rep ra hsym ih.1 ⟨h1, h2⟩ h3 h4,
      CumOK_frame ih.2 (Solution.build_cumFrame I _ ra c)
        (fun q hq => upd_other _ _ _ _ (by simpa using hq))⟩
  | remove ra r v t _ hA ht ih =>
    exact ⟨(remove_vertex_ok ra ih.1 (hA ▸ List.IsRotated.refl _) ht).1,
      CumOK_frame ih.2 (Solution.remove_vertex_cumFrame I _ ra r v)
        (fun q hq => upd_other _ _ _ _ (by simpa using hq))⟩
  | insert ra r w v t _ hA hv hv1 h1 h2 ih =>
    exact ⟨(insert_vertex_ok ra ih.1 (hA ▸ List.IsRotated.refl _) hv hv1 ⟨h1, h2⟩).1,
      CumOK_frame ih.2 (Solution.insert_vertex_cumFrame I _ ra r w v)
        (fun q hq => upd_other _ _ _ _ (by simpa using hq))⟩
  | remove_route ra r _ hA ih =>
    exact ⟨remove_route_ok ra ih.1 hA,
      CumOK_frame ih.2 (Solution.remove_route_cumFrame _ ra r)
        (fun q hq => upd_other _ _ _ _ (by simpa using hq))⟩
  | reverse ra r a b xs ys _ hA hx hb e ih =>
    have hlen : xs.length < fuel := by
      have h1 := ih.1.length_le r
      rw [hA] at h1
      simp only [List.length_cons, List.length_append] at h1
      omega
    obtain ⟨s4, e4, h4, _⟩ := reverse_ok ra hsym ih.1 (by rw [hA]) hx hb hlen
    have : s4 = _ := Option.some.inj (e4.symm.trans e)
    rw [this] at h4
    exact ⟨h4, CumOK_frame ih.2 (Solution.reverse_cumFrame I _ _ ra r a b fuel e)
      (fun q hq => upd_other _ _ _ _ (by simpa using hq))⟩
  | append R S LR LS _ hRS hAR hAS hLR hLS e ih =>
    have hlen : LS.length < fuel := by
      have h1 := ih.1.length_le S
      rw [hAS] at h1
      simp only [List.length_cons] at h1
      omega
    obtain ⟨s9, e9, h9, _⟩ := append_route_rep ih.1 hRS hAR hAS hLR hLS hlen
    have : s9 = _ := Option.some.inj (e9.symm.trans e)
    rw [this] at h9
    refine ⟨h9, CumOK_frame ih.2 (Solution.append_cumFrame I _ _ R S fuel e) (fun q hq => ?_)⟩
    have hq2 : q ≠ R ∧ q ≠ S := by simpa using hq
    rw [upd_other _ _ _ _ hq2.1, upd_other _ _ _ _ hq2.2]
  | flag r _ ih =>
    refine ⟨Rep_of_agree ih.1 (fun u => ⟨rfl, rfl, rfl, rfl⟩) (fun q => ?_) rfl rfl,
      CumOK_frame ih.2 (Solution.flag_cumFrame _ r) (fun q _ => rfl)⟩
    unfold RouteNode.agree
    simp
  | load_before r c x _ h0 hc hc0 e ih =>
    obtain ⟨t, ht⟩ := exists_rotated_cons h0
    have hct : c ∈ t := by
      have := ht.mem_iff.1 hc
      simp only [List.mem_cons] at this
      exact this.resolve_left hc0
    obtain ⟨s3, e3, h3, h4, _⟩ := Solution.refresh_spec ih.1 ih.2 ht hct hf
    unfold Solution.get_route_load_before_included at e
    rw [e3] at e
    simp only [Option.map_some', Option.some.injEq, Prod.mk.injEq] at e
    rw [← e.2]
    exact ⟨h3, h4⟩
  | load_after r c x _ h0 hc hc0 e ih =>
    obtain ⟨t, ht⟩ := exists_rotated_cons h0
    have hct : c ∈ t := by
      have := ht.mem_iff.1 hc
      simp only [List.mem_cons] at this
      exact this.resolve_left hc0
    obtain ⟨s3, e3, h3, h4, _⟩ := Solution.refresh_spec ih.1 ih.2 ht hct hf
    unfold Solution.get_route_load_after_included at e
    rw [e3] at e
    simp only [Option.map_some', Option.some.injEq, Prod.mk.injEq] at e
    rw [← e.2]
    exact ⟨h3, h4⟩
/-! ## The solutions of the small instance are represented -/

theorem lineInstance_sym : CostSym lineInstance :=
  ⟨fun i j => by show (i - j) * (i - j) = (j - i) * (j - i); ring,
   fun i => by show (i - i) * (i - i) = 0; ring⟩

theorem lineOne_rep : Rep lineInstance lineOne lineOneA ∧ CostOK lineInstance lineOne lineOneA :=
  ⟨build_rep false lineInstance_sym (fresh_rep lineInstance 5) (by decide) (by decide) (by decide),
   build_costOK false lineInstance_sym (fresh_rep lineInstance 5) (fresh_costOK lineInstance 5)
     (by decide)⟩

theorem lineTwo_rep : Rep lineInstance lineTwo lineTwoA ∧ CostOK lineInstance lineTwo lineTwoA :=
  ⟨insert_vertex_rep false lineOne_rep.1 (by decide) (by decide) (by decide) (by decide),
   insert_vertex_costOK false lineOne_rep.1 lineOne_rep.2 (by decide) (by decide)⟩

theorem lineBoth_rep : Rep lineInstance lineBoth lineBothA ∧ CostOK lineInstance lineBoth lineBothA :=
  ⟨build_rep false lineInstance_sym lineOne_rep.1 (by decide) (by decide) (by decide),
   build_costOK false lineInstance_sym lineOne_rep.1 lineOne_rep.2 (by decide)⟩

theorem some_getD_of_isSome {α : Type} {o : Option α} {d : α} (h : o.isSome = true) :
    o = some (o.getD d) := by
  cases o with
  | none => cases h
  | some x => rfl

/-- The recorded trajectory from `lineBoth` to `lineChain`. -/
theorem lineChain_traj : Traj lineInstance 4 lineBoth none lineChain :=
  Traj.build 3
    (Traj.reverse 1 1 2
      (Traj.remove_route 2
        (Traj.insert 1 0 2
          (Traj.empty 2 2 Traj.start (by decide) (by unfold Solution.linked; decide) (by decide)
            (by decide))
          (by unfold Solution.linked; decide) (Or.inr (by decide)) (by decide)))
      (by unfold Solution.linked; decide) (by unfold Solution.linked; decide) (by decide)
      (by decide) (some_getD_of_isSome (by decide)) (by decide))
    (by decide) (by decide) (by decide) (by decide)


/-- The cache of `lineOne` holds customer 1 only and has capacity 5. -/
theorem lineOne_cache : lineOne.cache.Holds [1] ∧ lineOne.cache.cache_size = (5 : Nat) := by
  have h : lineOne.cache = (LRUCache.create (5 : Nat)).insert 1 := by
    have h1 := (Solution.build_scalars lineInstance lineEmpty false 1).2.2.2.2.2.2
    have h2 : lineEmpty.cache = LRUCache.create 5 :=
      (Solution.fresh_fields lineInstance 5).2.2.2.2.2.1
    rw [h2] at h1
    exact h1
  rw [h]
  exact LRUCache.insert_holds (LRUCache.create (5 : Nat)) 5 [] 1 (LRUCache.create_holds 5) rfl
    (by decide) (by decide)

/-- The linked list of routes of `lineBoth`: route 2, built last, comes first. -/
theorem lineBoth_routeList : lineBoth.RouteList [2, 1] :=
  ⟨by decide, by decide, ⟨by decide, by decide, by decide, by decide, trivial⟩, by decide⟩

/-- The solution `lineTwo` is reached from the fresh solution by `build_one_customer_route(1)`
and `insert_vertex_before(1, depot, 2)`. -/
theorem lineTwo_mutated : Mutated lineInstance 5 lineTwo lineTwoA :=
  Mutated.insert false 1 0 2 [1]
    (Mutated.build false 1 (Mutated.fresh 5) (by decide) (by decide) (by decide) (by decide))
    (by decide) (by decide) (by decide) (by decide) (by decide)
/-! ## The claims -/

/-- C1: on a represented solution whose stored total cost is the sum of the arc costs of
its routes, for a symmetric cost function that vanishes on the diagonal,
`build_one_customer_route` (of an unserved customer, the route pool not being empty),
`remove_vertex` (of a vertex of a route that has another vertex, customer or depot) and
`insert_vertex_before` (before a vertex of the route, of an unserved customer or of the
depot the route is missing) each yield a solution that is again represented by cycles `B`,
whose stored total cost is the sum of the arc costs of these cycles, which are the costs
`get_route_cost` computes for the routes that have their depot, and in which every linked
vertex caches `cost(prev(v), v)`. -/
theorem cost_invariant_preserved (I : Instance) (hsym : CostSym I) (s : Solution)
    (A : Nat → List Int) (hR : Rep I s A) (hC : CostOK I s A) (ra : Bool) :
    (∀ c, 0 < c → c < (I.vertices_num : Int) → (s.customers_list c).route_ptr = 0 →
      s.routes_pool.begin < s.routes_pool.capacity →
      ∃ B, Rep I (Solution.build_one_customer_route I s ra c).2 B ∧
        CostOK I (Solution.build_one_customer_route I s ra c).2 B ∧
        (Solution.build_one_customer_route I s ra c).2.RouteCostsOK I B ∧
        (Solution.build_one_customer_route I s ra c).2.CachedOK I) ∧
    (∀ r v, v ∈ A r → (∃ u ∈ A r, u ≠ v) →
      ∃ B, Rep I (Solution.remove_vertex I s ra r v).1 B ∧
        CostOK I (Solution.remove_vertex I s ra r v).1 B ∧
        (Solution.remove_vertex I s ra r v).1.RouteCostsOK I B ∧
        (Solution.remove_vertex I s ra r v).1.CachedOK I) ∧
    (∀ r w v, w ∈ A r → v ∉ A r → (v ≠ 0 → (s.customers_list v).route_ptr = 0) →
      0 ≤ v → v < (I.vertices_num : Int) →
      ∃ B, Rep I (Solution.insert_vertex_before I s ra r w v) B ∧
        CostOK I (Solution.insert_vertex_before I s ra r w v) B ∧
        (Solution.insert_vertex_before I s ra r w v).RouteCostsOK I B ∧
        (Solution.insert_vertex_before I s ra r w v).CachedOK I) := by
  refine ⟨?_, ?_, ?_⟩
  · intro c h1 h2 h3 h4
    have h := build_rep ra hsym hR ⟨h1, h2⟩ h3 h4
    exact ⟨_, h, build_costOK ra hsym hR hC h4, h.routeCostsOK, h.cachedOK⟩
  · intro r v hv hu
    obtain ⟨t, ht, hne⟩ := exists_rotated_of_mem_ne hv hu
    have hR2 := Rep_isRotated hR ht
    have hC2 := CostOK_isRotated hC ht
    have h := remove_vertex_rep ra hR2 (upd_same A r (v :: t)) hne
    exact ⟨_, h, remove_vertex_costOK ra hR2 hC2 (upd_same A r (v :: t)) hne, h.routeCostsOK,
      h.cachedOK⟩
  · intro r w v hw hv hv1 h1 h2
    obtain ⟨t, ht⟩ := exists_rotated_cons hw
    have hR2 := Rep_isRotated hR ht
    have hC2 := CostOK_isRotated hC ht
    have hv2 : v ∉ upd A r (w :: t) r := by
      rw [upd_same]
      exact fun h => hv (ht.mem_iff.2 h)
    have h := insert_vertex_rep ra hR2 (upd_same A r (w :: t)) hv2 hv1 ⟨h1, h2⟩
    exact ⟨_, h, insert_vertex_costOK ra hR2 hC2 (upd_same A r (w :: t)) hv2, h.routeCostsOK,
      h.cachedOK⟩

theorem cost_invariant_preserved_witness :
    (∃ B, Rep lineInstance (Solution.build_one_customer_route lineInstance lineTwo true 3).2 B ∧
        CostOK lineInstance (Solution.build_one_customer_route lineInstance lineTwo true 3).2 B ∧
        (Solution.build_one_customer_route lineInstance lineTwo true 3).2.RouteCostsOK lineInstance B ∧
        (Solution.build_one_customer_route lineInstance lineTwo true 3).2.CachedOK lineInstance) ∧
    (∃ B, Rep lineInstance (Solution.remove_vertex lineInstance lineTwo true 1 0).1 B ∧
        CostOK lineInstance (Solution.remove_vertex lineInstance lineTwo true 1 0).1 B ∧
        (Solution.remove_vertex lineInstance lineTwo true 1 0).1.RouteCostsOK lineInstance B ∧
        (Solution.remove_vertex lineInstance lineTwo true 1 0).1.CachedOK lineInstance) ∧
    (∃ B, Rep lineInstance (Solution.insert_vertex_before lineInstance lineTwo true 1 2 3) B ∧
        CostOK lineInstance (Solution.insert_vertex_before lineInstance lineTwo true 1 2 3) B ∧
        (Solution.insert_vertex_before lineInstance lineTwo true 1 2 3).RouteCostsOK lineInstance B ∧
        (Solution.insert_vertex_before lineInstance lineTwo true 1 2 3).CachedOK lineInstance) :=
  ⟨(cost_invariant_preserved lineInstance lineInstance_sym lineTwo lineTwoA lineTwo_rep.1
      lineTwo_rep.2 true).1 3 (by decide) (by decide) (by decide) (by decide),
   (cost_invariant_preserved lineInstance lineInstance_sym lineTwo lineTwoA lineTwo_rep.1
      lineTwo_rep.2 true).2.1 1 0 (by decide) ⟨1, by decide, by decide⟩,
   (cost_invariant_preserved lineInstance lineInstance_sym lineTwo lineTwoA lineTwo_rep.1
      lineTwo_rep.2 true).2.2 1 2 3 (by decide) (by decide) (by decide) (by decide) (by decide)⟩

/-- C2: the claim fails on the code when the path `a .. b` is the whole cycle. On the route
`depot, 1, 2, depot` of `lineTwo` (stored total cost 6, the sum of its arcs),
`reverse_route_path(1, 1, depot)` returns a solution whose route is `depot, 2, 1, depot`,
whose arcs still sum to 6, and whose stored total cost is 4: the cost was changed by
`-2 * cost(depot, 1)`. -/
theorem reverse_whole_cycle_cost :
    lineTwo.solution_cost = 6 ∧
    Solution.get_route_cost lineInstance lineTwo 1 5 = some 6 ∧
    lineTwo.get_prev_vertex 1 1 = 0 ∧
    (Solution.reverse_route_path lineInstance lineTwo true 1 1 0 5).map
      (fun s => (s.route_customers 1 5, Solution.get_route_cost lineInstance s 1 5,
        s.solution_cost)) = some (some [2, 1], some 6, 4) := by
  decide

/-- C6: the claim fails on the code when the path `a .. b` is the whole cycle. On the route
`depot, 1, 2, depot` of `lineTwo` (stored total cost 6), `reverse_route_path(1, 1, depot)`
followed by `reverse_route_path(1, depot, 1)` gives back the customer order `1, 2`, but the
stored total cost is 2: each of the two calls has subtracted `2 * cost(depot, 1)`. -/
theorem reverse_twice_whole_cycle_cost :
    lineTwo.route_customers 1 5 = some [1, 2] ∧ lineTwo.solution_cost = 6 ∧
    ((Solution.reverse_route_path lineInstance lineTwo true 1 1 0 5).bind
      (fun s => Solution.reverse_route_path lineInstance s true 1 0 1 5)).map
      (fun s => (s.route_customers 1 5, Solution.get_route_cost lineInstance s 1 5,
        s.solution_cost)) = some (some [1, 2], some 6, 2) := by
  decide

/-- C3: on a represented solution, after each of `build_one_customer_route` (unserved
customer, pool not empty), `remove_vertex` (a vertex of a route that has another vertex),
`insert_vertex_before` (before a vertex of the route, an unserved customer or the missing
depot), `reverse_route_path` (two distinct vertices of the route) and `append_route` (two
distinct routes that have their depot and customers), for every present route that has its
depot the walk from `first_customer` to the depot returns, the stored load of the route is
the sum of the demands of the customers met and its stored size is their number. -/
theorem load_size_invariant (I : Instance) (hsym : CostSym I) (s : Solution)
    (A : Nat → List Int) (hR : Rep I s A) (ra : Bool) :
    (∀ c, 0 < c → c < (I.vertices_num : Int) → (s.customers_list c).route_ptr = 0 →
      s.routes_pool.begin < s.routes_pool.capacity →
      (Solution.build_one_customer_route I s ra c).2.LoadOK I) ∧
    (∀ r v, v ∈ A r → (∃ u ∈ A r, u ≠ v) → (Solution.remove_vertex I s ra r v).1.LoadOK I) ∧
    (∀ r w v, w ∈ A r → v ∉ A r → (v ≠ 0 → (s.customers_list v).route_ptr = 0) →
      0 ≤ v → v < (I.vertices_num : Int) →
      (Solution.insert_vertex_before I s ra r w v).LoadOK I) ∧
    (∀ r a b fuel, a ∈ A r → b ∈ A r → a ≠ b → I.vertices_num ≤ fuel →
      ∃ s2, Solution.reverse_route_path I s ra r a b fuel = some s2 ∧ s2.LoadOK I) ∧
    (∀ r q fuel, r ≠ q → (0 : Int) ∈ A r → (0 : Int) ∈ A q → (∃ u ∈ A r, u ≠ 0) →
      (∃ u ∈ A q, u ≠ 0) → I.vertices_num ≤ fuel →
      ∃ s2, Solution.append_route I s r q fuel = some s2 ∧ s2.LoadOK I) := by
  refine ⟨?_, ?_, ?_, ?_, ?_⟩
  · intro c h1 h2 h3 h4
    exact (build_rep ra hsym hR ⟨h1, h2⟩ h3 h4).loadOK
  · intro r v hv hu
    obtain ⟨t, ht, hne⟩ := exists_rotated_of_mem_ne hv hu
    exact (remove_vertex_ok ra hR ht hne).1.loadOK
  · intro r w v hw hv hv1 h1 h2
    obtain ⟨t, ht⟩ := exists_rotated_cons hw
    exact (insert_vertex_ok ra hR ht hv hv1 ⟨h1, h2⟩).1.loadOK
  · intro r a b fuel ha hb hab hf
    obtain ⟨xs, ys, hA, hx, hl⟩ := exists_path_of_mem ha hb hab
    have hlen : xs.length < fuel := by
      have h1 := hR.length_le r
      have h2 := hA.perm.length_eq
      simp only [List.length_cons, List.length_append] at h2
      omega
    obtain ⟨s4, e, h, _⟩ := reverse_ok ra hsym hR hA hx hl hlen
    exact ⟨s4, e, h.loadOK⟩
  · intro r q fuel hrq h0r h0q hcr hcq hf
    obtain ⟨s9, LR, LS, e, _, _, h, _⟩ := append_route_ok hR hrq h0r h0q hcr hcq hf
    exact ⟨s9, e, h.loadOK⟩

theorem load_size_invariant_witness :
    (Solution.build_one_customer_route lineInstance lineBoth true 3).2.LoadOK lineInstance ∧
    (Solution.remove_vertex lineInstance lineBoth true 1 1).1.LoadOK lineInstance ∧
    (Solution.insert_vertex_before lineInstance lineBoth true 1 0 3).LoadOK lineInstance ∧
    (∃ s2, Solution.reverse_route_path lineInstance lineBoth true 1 1 0 4 = some s2 ∧
      s2.LoadOK lineInstance) ∧
    (∃ s2, Solution.append_route lineInstance lineBoth 1 2 4 = some s2 ∧
      s2.LoadOK lineInstance) :=
  ⟨(load_size_invariant lineInstance lineInstance_sym lineBoth lineBothA lineBoth_rep.1 true).1
      3 (by decide) (by decide) (by decide) (by decide),
   (load_size_invariant lineInstance lineInstance_sym lineBoth lineBothA lineBoth_rep.1 true).2.1
      1 1 (by decide) ⟨0, by decide, by decide⟩,
   (load_size_invariant lineInstance lineInstance_sym lineBoth lineBothA lineBoth_rep.1 true).2.2.1
      1 0 3 (by decide) (by decide) (by decide) (by decide) (by decide),
   (load_size_invariant lineInstance lineInstance_sym lineBoth lineBothA lineBoth_rep.1 true
      ).2.2.2.1 1 1 0 4 (by decide) (by decide) (by decide) (by decide),
   (load_size_invariant lineInstance lineInstance_sym lineBoth lineBothA lineBoth_rep.1 true
      ).2.2.2.2 1 2 4 (by decide) (by decide) (by decide) ⟨1, by decide, by decide⟩
      ⟨2, by decide, by decide⟩ (by decide)⟩

/-- C4: on a represented solution, `remove_vertex` (of a vertex of a route that has
another vertex), `insert_vertex_before` (before a vertex of the route, of an unserved
customer or of the depot the route is missing) and `reverse_route_path` (between two
distinct vertices of the route, the whole cycle included) each yield a solution in which
every vertex `u` linked in a route `q`, the depot included, satisfies
`get_prev_vertex(q, get_next_vertex(q, u)) = u` and
`get_next_vertex(q, get_prev_vertex(q, u)) = u`. -/
theorem links_stay_consistent (I : Instance) (hsym : CostSym I) (s : Solution)
    (A : Nat → List Int) (hR : Rep I s A) (ra : Bool) (r : Nat) :
    (∀ v, v ∈ A r → (∃ u ∈ A r, u ≠ v) → (Solution.remove_vertex I s ra r v).1.LinksOK) ∧
    (∀ w v, w ∈ A r → v ∉ A r → (v ≠ 0 → (s.customers_list v).route_ptr = 0) →
      0 ≤ v → v < (I.vertices_num : Int) →
      (Solution.insert_vertex_before I s ra r w v).LinksOK) ∧
    (∀ a b fuel, a ∈ A r → b ∈ A r → a ≠ b → I.vertices_num ≤ fuel →
      ∃ s2, Solution.reverse_route_path I s ra r a b fuel = some s2 ∧ s2.LinksOK) := by
  refine ⟨?_, ?_, ?_⟩
  · intro v hv hu
    obtain ⟨t, ht, hne⟩ := exists_rotated_of_mem_ne hv hu
    exact (remove_vertex_ok ra hR ht hne).1.linksOK
  · intro w v hw hv hv1 h1 h2
    obtain ⟨t, ht⟩ := exists_rotated_cons hw
    exact (insert_vertex_ok ra hR ht hv hv1 ⟨h1, h2⟩).1.linksOK
  · intro a b fuel ha hb hab hf
    obtain ⟨xs, ys, hA, hx, hl⟩ := exists_path_of_mem ha hb hab
    have hlen : xs.length < fuel := by
      have h1 := hR.length_le r
      have h2 := hA.perm.length_eq
      simp only [List.length_cons, List.length_append] at h2
      omega
    obtain ⟨s4, e, h, _⟩ := reverse_ok ra hsym hR hA hx hl hlen
    exact ⟨s4, e, h.linksOK⟩

theorem links_stay_consistent_witness :
    (Solution.remove_vertex lineInstance lineTwo true 1 0).1.LinksOK ∧
    (Solution.insert_vertex_before lineInstance lineTwo true 1 2 3).LinksOK ∧
    (∃ s2, Solution.reverse_route_path lineInstance lineTwo true 1 1 0 4 = some s2 ∧
      s2.LinksOK) :=
  ⟨(links_stay_consistent lineInstance lineInstance_sym lineTwo lineTwoA lineTwo_rep.1 true 1).1
      0 (by decide) ⟨1, by decide, by decide⟩,
   (links_stay_consistent lineInstance lineInstance_sym lineTwo lineTwoA lineTwo_rep.1 true 1).2.1
      2 3 (by decide) (by decide) (by decide) (by decide) (by decide),
   (links_stay_consistent lineInstance lineInstance_sym lineTwo lineTwoA lineTwo_rep.1 true 1).2.2
      1 0 4 (by decide) (by decide) (by decide) (by decide)⟩

/-- C5: on a represented solution, for a customer `v` linked in route `r` whose successor
`w` is another vertex (the depot when `v` is the last or the only customer),
`remove_vertex(r, v)` followed by `insert_vertex_before(r, w, v)` restores the stored
total cost, the predecessor, successor and route of every customer, and the first and last
customer, the load and the size of every route. -/
theorem remove_then_insert_restores (I : Instance) (s : Solution) (A : Nat → List Int)
    (hR : Rep I s A) (ra : Bool) (r : Nat) (v : Int) (hv0 : v ≠ 0) (hl : s.linked r v)
    (hw : s.get_next_vertex r v ≠ v) :
    (Solution.insert_vertex_before I (Solution.remove_vertex I s ra r v).1 ra r
        (s.get_next_vertex r v) v).solution_cost = s.solution_cost ∧
    SameRoutes I s (Solution.insert_vertex_before I (Solution.remove_vertex I s ra r v).1 ra r
        (s.get_next_vertex r v) v) := by
  have hv := (hR.linked_iff r v).1 hl
  obtain ⟨t, ht⟩ := exists_rotated_next hR hv hw
  obtain ⟨h1, c1⟩ := remove_vertex_ok ra hR ht (by simp)
  have hnd : (v :: s.get_next_vertex r v :: t).Nodup := ht.perm.nodup_iff.1 (hR.routes r).nodup
  have hA1 : upd A r (s.get_next_vertex r v :: t) r ~r (s.get_next_vertex r v :: t) := by
    rw [upd_same]
  have hv2 : v ∉ upd A r (s.get_next_vertex r v :: t) r := by
    rw [upd_same]
    exact (List.nodup_cons.1 hnd).1
  have hptr : ((Solution.remove_vertex I s ra r v).1.customers_list v).route_ptr = 0 := by
    refine h1.route_ptr_zero hv0 (fun q hq => ?_)
    by_cases e : q = r
    · subst e; exact hv2 hq
    · rw [upd_other _ _ _ _ e] at hq
      exact hR.not_mem_of_ne e hv0 hv hq
  obtain ⟨h2, c2⟩ := insert_vertex_ok ra h1 hA1 hv2 (fun _ => hptr) ((hR.routes r).range v hv)
  rw [upd_upd] at h2
  refine ⟨?_, Rep_agree hR h2 (fun q => ?_)⟩
  · rw [c2, c1]; ring
  · by_cases e : q = r
    · subst e; rw [upd_same]; exact ht
    · rw [upd_other _ _ _ _ e]

theorem remove_then_insert_restores_witness :
    (Solution.insert_vertex_before lineInstance (Solution.remove_vertex lineInstance lineTwo true 1 2).1
        true 1 (lineTwo.get_next_vertex 1 2) 2).solution_cost = lineTwo.solution_cost ∧
    SameRoutes lineInstance lineTwo
      (Solution.insert_vertex_before lineInstance (Solution.remove_vertex lineInstance lineTwo true 1 2).1
        true 1 (lineTwo.get_next_vertex 1 2) 2) :=
  remove_then_insert_restores lineInstance lineTwo lineTwoA lineTwo_rep.1 true 1 2 (by decide)
    (by unfold Solution.linked; decide) (by decide)

/-- C9: on a represented solution with a route left in the pool, for an unserved customer
`c` and a symmetric cost function, `build_one_customer_route(c)` returns a route that was
not in the solution; afterwards this route is in the solution, its first and last customer
are `c`, the predecessor and the successor of `c` are the depot (so the walk from
`first_customer` meets exactly `c`, and the solution is represented by the former routes and
the cycle `depot, c` for the new one), its load is `demand(c)` and its size 1; the number of
routes has grown by one, the stored total cost by `2 * cost(depot, c)`; every other route
and every other customer keep their first and last customer, load, size, presence, links
and route (only the list of routes is re-threaded, the new route becoming its head). -/
theorem build_one_customer_route_spec (I : Instance) (hsym : CostSym I) (s : Solution)
    (A : Nat → List Int)
    (hR : Rep I s A) (ra : Bool) (c : Int) (hc : 0 < c ∧ c < (I.vertices_num : Int))
    (hun : (s.customers_list c).route_ptr = 0)
    (hpool : s.routes_pool.begin < s.routes_pool.capacity) :
    (s.routes_list (Solution.build_one_customer_route I s ra c).1).in_solution = false ∧
    Rep I (Solution.build_one_customer_route I s ra c).2
      (upd A (Solution.build_one_customer_route I s ra c).1 [0, c]) ∧
    ((Solution.build_one_customer_route I s ra c).2.routes_list
      (Solution.build_one_customer_route I s ra c).1).in_solution = true ∧
    ((Solution.build_one_customer_route I s ra c).2.routes_list
      (Solution.build_one_customer_route I s ra c).1).first_customer = c ∧
    ((Solution.build_one_customer_route I s ra c).2.routes_list
      (Solution.build_one_customer_route I s ra c).1).last_customer = c ∧
    ((Solution.build_one_customer_route I s ra c).2.customers_list c).prev = 0 ∧
    ((Solution.build_one_customer_route I s ra c).2.customers_list c).next = 0 ∧
    ((Solution.build_one_customer_route I s ra c).2.customers_list c).route_ptr =
      (Solution.build_one_customer_route I s ra c).1 ∧
    (Solution.build_one_customer_route I s ra c).2.route_customers
      (Solution.build_one_customer_route I s ra c).1 (I.vertices_num + 1) = some [c] ∧
    ((Solution.build_one_customer_route I s ra c).2.routes_list
      (Solution.build_one_customer_route I s ra c).1).load = I.demand c ∧
    ((Solution.build_one_customer_route I s ra c).2.routes_list
      (Solution.build_one_customer_route I s ra c).1).size = 1 ∧
    (Solution.build_one_customer_route I s ra c).2.get_routes_num = s.get_routes_num + 1 ∧
    (Solution.build_one_customer_route I s ra c).2.solution_cost =
      s.solution_cost + 2 * I.cost 0 c ∧
    (∀ q, q ≠ (Solution.build_one_customer_route I s ra c).1 →
      RouteNode.agree ((Solution.build_one_customer_route I s ra c).2.routes_list q)
        (s.routes_list q)) ∧
    (∀ u, u ≠ c →
      CustomerNode.agree ((Solution.build_one_customer_route I s ra c).2.customers_list u)
        (s.customers_list u)) := by
  obtain ⟨a1, a2, a3, _⟩ := Solution.build_customer I s ra c
  obtain ⟨b1, b2, b3, b4, b5, _⟩ := Solution.build_route I s ra c
  obtain ⟨c1, _, _, _, _, c6, _⟩ := Solution.build_scalars I s ra c
  have habs := (hR.pool_absent s.routes_pool.begin (le_refl _) hpool).1
  have hpres : (s.routes_list (Solution.build_one_customer_route I s ra c).1).in_solution
      = false := by
    rw [Solution.build_route_eq]
    cases e : (s.routes_list (s.routes_pool.array s.routes_pool.begin)).in_solution
    · rfl
    · exact absurd habs ((hR.routes _).present_iff.2 e)
  have hwalk : (Solution.build_one_customer_route I s ra c).2.route_customers
      (Solution.build_one_customer_route I s ra c).1 (I.vertices_num + 1) = some [c] := by
    have hN : 2 ≤ I.vertices_num := by omega
    obtain ⟨n, hn⟩ : ∃ n, I.vertices_num + 1 = n + 2 := ⟨I.vertices_num - 1, by omega⟩
    unfold Solution.route_customers
    rw [b1, hn]
    simp [Solution.walk, a1, ne_of_gt hc.1]
  exact ⟨hpres, build_rep ra hsym hR hc hun hpool, b5, b1, b2, a2, a1, a3, hwalk, b3, b4, c6, c1,
    Solution.build_routes_list I s ra c, Solution.build_customers_list I s ra c⟩

theorem build_one_customer_route_spec_witness :
    (lineTwo.routes_list (Solution.build_one_customer_route lineInstance lineTwo true 3).1
      ).in_solution = false ∧
    (Solution.build_one_customer_route lineInstance lineTwo true 3).2.route_customers
      (Solution.build_one_customer_route lineInstance lineTwo true 3).1
      (lineInstance.vertices_num + 1) = some [3] ∧
    (Solution.build_one_customer_route lineInstance lineTwo true 3).2.solution_cost =
      lineTwo.solution_cost + 2 * lineInstance.cost 0 3 :=
  have h := build_one_customer_route_spec lineInstance lineInstance_sym lineTwo lineTwoA
    lineTwo_rep.1 true 3 (by decide) (by decide) (by decide)
  ⟨h.1, h.2.2.2.2.2.2.2.2.1, h.2.2.2.2.2.2.2.2.2.2.2.2.1⟩

/-- C10: after `build_one_customer_route(c)` on a solution whose cache has capacity at least
2, the customer `c` is a member of the set of recently modified vertices: it is its first
vertex, `get_svc_begin() = c`, hence it is met when iterating from `get_svc_begin`. The only
change of the cache is `cache.insert(c)`: the depot is not inserted. -/
theorem build_one_customer_route_svc (I : Instance) (s : Solution) (ra : Bool) (c : Int)
    (hc : 0 < c) (hcap : 2 ≤ s.cache.cache_size) (fuel : Nat) :
    (Solution.build_one_customer_route I s ra c).2.get_svc_begin = c ∧
    (Solution.build_one_customer_route I s ra c).2.cache.reaches (fuel + 1)
      (Solution.build_one_customer_route I s ra c).2.get_svc_begin c = true ∧
    (Solution.build_one_customer_route I s ra c).2.cache = s.cache.insert c := by
  have h := (Solution.build_scalars I s ra c).2.2.2.2.2.2
  have hb : (Solution.build_one_customer_route I s ra c).2.get_svc_begin = c := by
    unfold Solution.get_svc_begin
    rw [h]
    unfold LRUCache.insert LRUCache.splay_on_top
    by_cases h1 : (s.cache.cache c).used = true
    · simp only [h1, if_true]
      split_ifs <;> rfl
    · simp only [h1]
      split_ifs <;> rfl
  refine ⟨hb, ?_, h⟩
  rw [hb]
  have : c ≠ -1 := by omega
  simp [LRUCache.reaches, this]

theorem build_one_customer_route_svc_witness :
    (Solution.build_one_customer_route lineInstance lineEmpty true 1).2.get_svc_begin = 1 ∧
    (Solution.build_one_customer_route lineInstance lineEmpty true 1).2.cache.reaches (4 + 1)
      (Solution.build_one_customer_route lineInstance lineEmpty true 1).2.get_svc_begin 1
        = true ∧
    (Solution.build_one_customer_route lineInstance lineEmpty true 1).2.cache =
      lineEmpty.cache.insert 1 :=
  build_one_customer_route_svc lineInstance lineEmpty true 1 (by decide) (by decide) 4

/-- C10, counterexample: on the empty solution of `lineInstance`, whose cache has capacity
5, after `build_one_customer_route(1)` the iteration from `get_svc_begin` meets customer 1
and then ends; the depot is not met. -/
theorem build_one_customer_route_svc_depot :
    2 ≤ lineEmpty.cache.cache_size ∧
    (Solution.build_one_customer_route lineInstance lineEmpty true 1).2.get_svc_begin = 1 ∧
    (Solution.build_one_customer_route lineInstance lineEmpty true 1).2.get_svc_next 1 =
      (Solution.build_one_customer_route lineInstance lineEmpty true 1).2.get_svc_end ∧
    (Solution.build_one_customer_route lineInstance lineEmpty true 1).2.cache.reaches 5
      (Solution.build_one_customer_route lineInstance lineEmpty true 1).2.get_svc_begin 0
        = false := by
  decide

/-- C7, counterexample: `lineBoth` has the routes `1: depot, 1, depot` and
`2: depot, 2, depot` and empty do/undo lists. The recorded mutations `remove_vertex(2, 2)`,
`build_one_customer_route(3)`, `remove_vertex(3, 3)`, `insert_vertex_before(3, depot, 2)`,
`remove_route(2)` turn it into `lineLate`. Replaying the undo list of `lineLate` returns a
solution in which customer 2 is served by route 3 and route 2 is absent: when
`INSERT_VERTEX(2, depot, 2)` is replayed route 2 is absent and the pool hands out route 3. -/
theorem undo_late_route_removal :
    lineBoth.undo_list1 = [] ∧ lineBoth.do_list1 = [] ∧
    ((lineBoth.customers_list 2).route_ptr, (lineBoth.routes_list 2).in_solution,
      (lineBoth.routes_list 3).in_solution) = (2, true, false) ∧
    (Solution.apply_undo_list1 lineInstance lineLate lineLate 4).map
      (fun t => ((t.customers_list 2).route_ptr, (t.routes_list 2).in_solution,
        (t.routes_list 3).in_solution)) = some (3, false, true) := by
  decide

/-- C7: let `s0` be a represented solution whose stored cost is the sum of the arc costs
of its routes and whose undo list is empty, for a symmetric cost function vanishing on the
diagonal. If recorded mutations (`build_one_customer_route`, `remove_vertex`,
`insert_vertex_before`, `reverse_route_path` of a path that is not a whole cycle, and
`remove_route` of a route emptied by a recorded `remove_vertex` with only `remove_vertex`,
`insert_vertex_before`, `reverse_route_path` on other routes in between) turn `s0` into
`s`, then `apply_undo_list1` applied to `s` returns a solution with the predecessor,
successor and route of every customer of `s0`, the same routes in the solution under the
same identifiers, with the same first and last customer, load and size, and the same total
cost. -/
theorem undo_restores (I : Instance) (hsym : CostSym I) (fuel : Nat)
    (hf : I.vertices_num ≤ fuel) (s0 s : Solution) (A0 : Nat → List Int) (hR : Rep I s0 A0)
    (hC : CostOK I s0 A0) (h0 : s0.undo_list1 = []) (ht : Traj I fuel s0 none s) :
    ∃ t, Solution.apply_undo_list1 I s s fuel = some t ∧ SameRoutes I s0 t ∧
      t.solution_cost = s0.solution_cost := by
  obtain ⟨A, hA, hCA, _, hback⟩ := Traj.rewinds hsym hf hR hC h0 ht
  obtain ⟨t, B, e, hB, hCB, hrot, hm, _⟩ :=
    hback s A hA hCA rfl ⟨fun q => List.IsRotated.refl _, PoolEq.refl _⟩
  refine ⟨t, e, Rep_agree hR hB hrot, ?_⟩
  unfold CostOK at hC hCB
  rw [hCB, hC, hm]
  exact Finset.sum_congr rfl (fun q _ => cycCost_isRotated (hrot q))

theorem undo_restores_witness :
    ∃ t, Solution.apply_undo_list1 lineInstance lineRemoved lineRemoved 4 = some t ∧
      SameRoutes lineInstance lineBoth t ∧ t.solution_cost = lineBoth.solution_cost :=
  undo_restores lineInstance lineInstance_sym 4 (by decide) lineBoth lineRemoved lineBothA
    lineBoth_rep.1 lineBoth_rep.2 (by decide)
    (Traj.remove_route 1 (Traj.empty 1 1 Traj.start (by decide)
      (by unfold Solution.linked; decide) (by decide) (by decide)))

/-- Whole-cycle reversal under undo and redo. From `lineTwo` (route `depot, 1, 2, depot`,
total cost 6, empty lists) the recorded call `reverse_route_path(1, 1, depot)` leads to a
solution `s` of stored cost 4; applying the undo list of `s` to `s` and then its do list to
the result gives the links of `s` back but the stored cost 0. -/
theorem redo_after_undo_whole_cycle :
    lineTwo.undo_list1 = [] ∧ lineTwo.do_list1 = [] ∧
    (Solution.reverse_route_path lineInstance lineTwo true 1 1 0 4).map
      (fun s => (s.solution_cost, (s.customers_list 1).next, (s.customers_list 1).prev,
        (s.customers_list 2).next, (s.customers_list 2).prev)) = some (4, 0, 2, 1, 0) ∧
    ((Solution.reverse_route_path lineInstance lineTwo true 1 1 0 4).bind
      (fun s => (Solution.apply_undo_list1 lineInstance s s 4).bind
        (fun t => Solution.apply_do_list1 lineInstance s t 4))).map
      (fun s => (s.solution_cost, (s.customers_list 1).next, (s.customers_list 1).prev,
        (s.customers_list 2).next, (s.customers_list 2).prev)) = some (0, 0, 2, 1, 0) := by
  decide

/-- C8, counterexample: `lineLate` is reached from `lineBoth` (empty do/undo lists) by the
recorded mutations `remove_vertex(2, 2)`, `build_one_customer_route(3)`,
`remove_vertex(3, 3)`, `insert_vertex_before(3, depot, 2)`, `remove_route(2)`; it has the
routes `1: depot, 1, depot` and `3: depot, 2, depot` and total cost 10. Applying its undo
list to it and then its do list to the result returns a solution in which customer 2 is its
own predecessor and successor and the total cost is 6: the undo has put customer 2 on
route 3, so the replayed `remove_vertex(2, 2)` and `insert_vertex_before(3, depot, 2)` act
on the wrong routes. -/
theorem redo_after_undo_late_route_removal :
    lineBoth.undo_list1 = [] ∧ lineBoth.do_list1 = [] ∧
    ((lineLate.customers_list 2).next, (lineLate.customers_list 2).prev,
      lineLate.solution_cost) = (0, 0, 10) ∧
    ((Solution.apply_undo_list1 lineInstance lineLate lineLate 4).bind
      (fun t => Solution.apply_do_list1 lineInstance lineLate t 4)).map
      (fun u => ((u.customers_list 2).next, (u.customers_list 2).prev, u.solution_cost))
      = some (2, 2, 6) := by
  decide

/-- C8: let `s0` be a represented solution whose stored cost is the sum of the arc costs
of its routes and whose do and undo lists are empty, for a symmetric cost function
vanishing on the diagonal. If a trajectory of recorded mutations (`build_one_customer_route`,
`remove_vertex`, `insert_vertex_before`, `reverse_route_path` of a path that is not a whole
cycle, and `remove_route` of a route emptied by a recorded `remove_vertex` with only
`remove_vertex`, `insert_vertex_before`, `reverse_route_path` on other routes in between)
leads from `s0` to `s`, then applying the undo list of `s` to `s` and the do list of `s` to
the result returns a solution with the predecessor, successor and route of every customer
of `s`, the same routes with the same first and last customer, load and size, and the total
cost of `s`; in particular it is equal to `s` under `Solution::operator==`. -/
theorem redo_after_undo (I : Instance) (hsym : CostSym I) (fuel : Nat)
    (hf : I.vertices_num ≤ fuel) (s0 s : Solution) (A0 : Nat → List Int) (hR : Rep I s0 A0)
    (hC : CostOK I s0 A0) (hu : s0.undo_list1 = []) (hd : s0.do_list1 = [])
    (ht : Traj I fuel s0 none s) :
    ∃ t u, Solution.apply_undo_list1 I s s fuel = some t ∧
      Solution.apply_do_list1 I s t fuel = some u ∧ SameRoutes I s u ∧
      u.solution_cost = s.solution_cost := by
  obtain ⟨A, hA, hCA, _, hback⟩ := Traj.rewinds hsym hf hR hC hu ht
  obtain ⟨t, B0, e, hB0, hCB0, hrot0, hm0, hpe0⟩ :=
    hback s A hA hCA rfl ⟨fun q => List.IsRotated.refl _, PoolEq.refl _⟩
  obtain ⟨A2, ⟨hA2, hCA2, hfwd⟩, _⟩ := Traj.replays hsym hf hR hC hd ht
  obtain ⟨u, B, e2, hB, hCB, hrot, hm, _⟩ := hfwd t B0 hB0 hCB0 hm0 hrot0 hpe0
  refine ⟨t, u, e, e2, Rep_agree hA2 hB hrot, ?_⟩
  unfold CostOK at hCA2 hCB
  rw [hCB, hCA2, hm]
  exact Finset.sum_congr rfl (fun q _ => (cycCost_isRotated (hrot q)))

theorem redo_after_undo_witness :
    ∃ t u, Solution.apply_undo_list1 lineInstance lineChain lineChain 4 = some t ∧
      Solution.apply_do_list1 lineInstance lineChain t 4 = some u ∧
      SameRoutes lineInstance lineChain u ∧ u.solution_cost = lineChain.solution_cost :=
  redo_after_undo lineInstance lineInstance_sym 4 (by decide) lineBoth lineChain lineBothA
    lineBoth_rep.1 lineBoth_rep.2 (by decide) (by decide) lineChain_traj

/-! ## The heap order while an element is sifted -/

theorem PARENT_lt {k : Nat} (h : 0 < k) : MGHeap.PARENT k < k := by
  unfold MGHeap.PARENT; omega

theorem PARENT_LEFT (h : Nat) : MGHeap.PARENT (MGHeap.LEFT h) = h := by
  unfold MGHeap.PARENT MGHeap.LEFT; omega

theorem PARENT_RIGHT (h : Nat) : MGHeap.PARENT (MGHeap.RIGHT h) = h := by
  unfold MGHeap.PARENT MGHeap.RIGHT; omega

theorem child_of_PARENT {c h : Nat} (hc : 0 < c) (hp : MGHeap.PARENT c = h) :
    c = MGHeap.LEFT h ∨ c = MGHeap.RIGHT h := by
  unfold MGHeap.PARENT at hp
  unfold MGHeap.LEFT MGHeap.RIGHT
  omega

theorem HeapOrd.up {key : Nat → Int} {n : Nat} (h : HeapOrd key n) (p : Nat) : UpOrd key n p :=
  ⟨fun k h0 hn _ => h k h0 hn, fun c h0 hn hp hp0 => by
    have h1 := h c h0 hn
    have h2 := h p hp0 (by have := PARENT_lt h0; omega)
    rw [hp] at h1
    exact le_trans h2 h1⟩

theorem HeapOrd.down {key : Nat → Int} {n : Nat} (h : HeapOrd key n) (p : Nat) :
    DownOrd key n p :=
  ⟨fun k h0 hn _ => h k h0 hn, (h.up p).2⟩

/-- The key at position `h` of a heap is replaced by a smaller one. -/
theorem UpOrd_of_change {key key2 : Nat → Int} {n h : Nat} (ho : HeapOrd key n)
    (hk : ∀ k, k < n → k ≠ h → key2 k = key k) (hle : key2 h ≤ key h) : UpOrd key2 n h := by
  refine ⟨fun k h0 hn hkh => ?_, fun c h0 hn hp hp0 => ?_⟩
  · have hpn : MGHeap.PARENT k < n := by have := PARENT_lt h0; omega
    rw [hk k hn hkh]
    by_cases hpk : MGHeap.PARENT k = h
    · rw [hpk]
      have := ho k h0 hn
      rw [hpk] at this
      exact le_trans hle this
    · rw [hk _ hpn hpk]
      exact ho k h0 hn
  · have hch : c ≠ h := by have := PARENT_lt h0; omega
    have hph : MGHeap.PARENT h ≠ h := by have := PARENT_lt hp0; omega
    have hpn : MGHeap.PARENT h < n := by
      have := PARENT_lt h0
      have := PARENT_lt hp0
      omega
    rw [hk c hn hch, hk _ hpn hph]
    exact (ho.up h).2 c h0 hn hp hp0

/-- The key at position `h` of a heap is replaced by a larger one. -/
theorem DownOrd_of_change {key key2 : Nat → Int} {n h : Nat} (ho : HeapOrd key n)
    (hk : ∀ k, k < n → k ≠ h → key2 k = key k) (hle : key h ≤ key2 h) : DownOrd key2 n h := by
  refine ⟨fun k h0 hn hpk => ?_, fun c h0 hn hp hp0 => ?_⟩
  · have hpn : MGHeap.PARENT k < n := by have := PARENT_lt h0; omega
    rw [hk _ hpn hpk]
    by_cases hkh : k = h
    · rw [hkh]
      have := ho k h0 hn
      rw [hkh] at this
      exact le_trans this hle
    · rw [hk k hn hkh]
      exact ho k h0 hn
  · have hch : c ≠ h := by have := PARENT_lt h0; omega
    have hph : MGHeap.PARENT h ≠ h := by have := PARENT_lt hp0; omega
    have hpn : MGHeap.PARENT h < n := by
      have := PARENT_lt h0
      have := PARENT_lt hp0
      omega
    rw [hk c hn hch, hk _ hpn hph]
    exact (ho.up h).2 c h0 hn hp hp0

theorem UpOrd_done {key : Nat → Int} {n h : Nat} (hu : UpOrd key n h)
    (hd : h = 0 ∨ key (MGHeap.PARENT h) ≤ key h) : HeapOrd key n := by
  intro k h0 hn
  by_cases hkh : k = h
  · subst hkh
    rcases hd with hd | hd
    · omega
    · exact hd
  · exact hu.1 k h0 hn hkh

theorem DownOrd_done {key : Nat → Int} {n h : Nat} (hu : DownOrd key n h)
    (hl : MGHeap.LEFT h < n → key h ≤ key (MGHeap.LEFT h))
    (hr : MGHeap.RIGHT h < n → key h ≤ key (MGHeap.RIGHT h)) : HeapOrd key n := by
  intro k h0 hn
  by_cases hpk : MGHeap.PARENT k = h
  · rw [hpk]
    rcases child_of_PARENT h0 hpk with e | e
    · rw [e] at hn ⊢; exact hl hn
    · rw [e] at hn ⊢; exact hr hn
  · exact hu.1 k h0 hn hpk

/-- One pass of the loop of `upsift`: the parent is moved down. -/
theorem UpOrd_step {key key2 : Nat → Int} {n h : Nat} (hu : UpOrd key n h) (h0 : 0 < h)
    (hn : h < n) (hlt : key h < key (MGHeap.PARENT h))
    (hp : key2 (MGHeap.PARENT h) = key h) (hh : key2 h = key (MGHeap.PARENT h))
    (hk : ∀ k, k ≠ h → k ≠ MGHeap.PARENT h → key2 k = key k) :
    UpOrd key2 n (MGHeap.PARENT h) := by
  have hph := PARENT_lt h0
  refine ⟨fun k k0 kn hkp => ?_, fun c c0 cn hcp hp0 => ?_⟩
  · by_cases hkh : k = h
    · subst hkh
      rw [hp, hh]
      exact le_of_lt hlt
    · rw [hk k hkh hkp]
      by_cases e1 : MGHeap.PARENT k = MGHeap.PARENT h
      · rw [e1, hp]
        have := hu.1 k k0 kn hkh
        rw [e1] at this
        exact le_trans (le_of_lt hlt) this
      · by_cases e2 : MGHeap.PARENT k = h
        · rw [e2, hh]
          exact hu.2 k k0 kn e2 h0
        · rw [hk _ e2 e1]
          exact hu.1 k k0 kn hkh
  · have hpp := PARENT_lt hp0
    have e1 : MGHeap.PARENT (MGHeap.PARENT h) ≠ h := by omega
    have e2 : MGHeap.PARENT (MGHeap.PARENT h) ≠ MGHeap.PARENT h := by omega
    rw [hk _ e1 e2]
    have hpn : MGHeap.PARENT h < n := by omega
    have a1 := hu.1 (MGHeap.PARENT h) hp0 hpn (by omega)
    by_cases hch : c = h
    · subst hch
      rw [hh]
      exact a1
    · have hcp2 : c ≠ MGHeap.PARENT h := by have := PARENT_lt c0; omega
      rw [hk c hch hcp2]
      have a2 := hu.1 c c0 cn hch
      rw [hcp] at a2
      exact le_trans a1 a2

/-- One pass of the loop of `heapify`: the smaller child `sm` is moved up. -/
theorem DownOrd_step {key key2 : Nat → Int} {n h sm : Nat} (hd : DownOrd key n h)
    (hsm : sm = MGHeap.LEFT h ∨ sm = MGHeap.RIGHT h) (hn : sm < n)
    (hlt : key sm < key h)
    (hl : MGHeap.LEFT h < n → key sm ≤ key (MGHeap.LEFT h))
    (hr : MGHeap.RIGHT h < n → key sm ≤ key (MGHeap.RIGHT h))
    (hs : key2 sm = key h) (hh : key2 h = key sm)
    (hk : ∀ k, k ≠ h → k ≠ sm → key2 k = key k) :
    DownOrd key2 n sm := by
  have hps : MGHeap.PARENT sm = h := by
    rcases hsm with e | e
    · rw [e]; exact PARENT_LEFT h
    · rw [e]; exact PARENT_RIGHT h
  have hsm0 : 0 < sm := by
    rcases hsm with e | e
    · rw [e]; unfold MGHeap.LEFT; omega
    · rw [e]; unfold MGHeap.RIGHT; omega
  have hhs : h < sm := by have := PARENT_lt hsm0; omega
  refine ⟨fun k k0 kn hkp => ?_, fun c c0 cn hcp _ => ?_⟩
  · by_cases hkh : k = h
    · subst hkh
      have e1 : MGHeap.PARENT k ≠ k := by have := PARENT_lt k0; omega
      rw [hh, hk _ e1 hkp]
      have a1 := hd.2 sm hsm0 hn hps k0
      exact a1
    · by_cases hks : k = sm
      · subst hks
        rw [hps, hs, hh]
        exact le_of_lt hlt
      · rw [hk k hkh hks]
        by_cases e2 : MGHeap.PARENT k = h
        · rw [e2, hh]
          rcases child_of_PARENT k0 e2 with e | e
          · rw [e] at kn ⊢; exact hl kn
          · rw [e] at kn ⊢; exact hr kn
        · rw [hk _ e2 hkp]
          exact hd.1 k k0 kn e2
  · rw [hps, hh]
    have hch : c ≠ h := by have := PARENT_lt c0; omega
    have hcs : c ≠ sm := by have := PARENT_lt c0; omega
    rw [hk c hch hcs]
    have := hd.1 c c0 cn (by omega)
    rw [hcp] at this
    exact this
/-! ## The loops of `upsift` and `heapify` -/

/-- The hole moves from `h` to `h2`: the generator at `h2` is written to `h`, with its new
heap index. -/
theorem HoleIdx_move {heap : Nat → Nat} {n : Nat} {hidx : Nat → Int} {h h2 elem : Nat}
    (hi : HoleIdx (upd heap h elem) n hidx h) (hn : h < n) (hn2 : h2 < n) (hne : h2 ≠ h) :
    HoleIdx (upd (upd heap h (heap h2)) h2 elem) n (upd hidx (heap h2) (h : Int)) h2 := by
  obtain ⟨i1, i2, i3⟩ := hi
  have e2 : ∀ k, upd (upd heap h (heap h2)) h2 elem k =
      upd heap h elem (if k = h2 then h else if k = h then h2 else k) := by
    intro k
    by_cases k1 : k = h2
    · simp [upd, k1]
    · by_cases k2 : k = h
      · simp [upd, k2, hne, Ne.symm hne]
      · simp [upd, k1, k2]
  have hsw : ∀ k, k < n → (if k = h2 then h else if k = h then h2 else k) < n := by
    intro k hk
    split_ifs <;> assumption
  refine ⟨fun a b ha hb hab => ?_, fun k hk hk2 => ?_, fun m hm => ?_⟩
  · rw [e2 a, e2 b] at hab
    have := i1 _ _ (hsw a ha) (hsw b hb) hab
    split_ifs at this <;> omega
  · by_cases k2 : k = h
    · subst k2
      simp [upd, hk2]
    · have hk3 : upd (upd heap h (heap h2)) h2 elem k = heap k := by simp [upd, hk2, k2]
      rw [hk3]
      have hne2 : heap k ≠ heap h2 := by
        intro e
        have a1 : upd heap h elem k = heap k := by simp [upd, k2]
        have a2 : upd heap h elem h2 = heap h2 := by simp [upd, hne]
        exact hk2 (i1 k h2 hk hn2 (by rw [a1, a2, e]))
      have := i2 k hk k2
      simp only [upd, k2, if_false] at this
      simp [upd, hne2, this]
  · have hm2 : ∀ k, k < n → upd heap h elem k ≠ m := by
      intro k hk
      have := hm (if k = h2 then h else if k = h then h2 else k) (hsw k hk)
      rw [e2] at this
      by_cases k1 : k = h2
      · simpa [k1, hne, Ne.symm hne] using this
      · by_cases k2 : k = h
        · simpa [k2, hne, Ne.symm hne] using this
        · simpa [k1, k2] using this
    have hmh : m ≠ heap h2 := by
      have := hm h hn
      simp only [upd, Ne.symm hne, if_false, if_true] at this
      exact fun e => this e.symm
    simp [upd, hmh, i3 m hm2]

/-- The element is written into the hole. -/
theorem HoleIdx_fill {heap : Nat → Nat} {n : Nat} {hidx : Nat → Int} {h elem : Nat}
    (hi : HoleIdx (upd heap h elem) n hidx h) (hn : h < n) :
    (∀ a b, a < n → b < n → upd heap h elem a = upd heap h elem b → a = b) ∧
    (∀ k, k < n → upd hidx elem (h : Int) (upd heap h elem k) = k) ∧
    (∀ m, (∀ k, k < n → upd heap h elem k ≠ m) → upd hidx elem (h : Int) m = -1) := by
  obtain ⟨i1, i2, i3⟩ := hi
  refine ⟨i1, fun k hk => ?_, fun m hm => ?_⟩
  · by_cases k2 : k = h
    · subst k2
      simp [upd]
    · have hne : upd heap k.succ.pred elem k = upd heap k elem k := rfl
      have hke : upd heap h elem k ≠ elem := by
        intro e
        have a2 : upd heap h elem h = elem := by simp [upd]
        exact k2 (i1 k h hk hn (by rw [e, a2]))
      have := i2 k hk k2
      simp only [upd] at hke this ⊢
      simp [hke, this]
  · have hme : m ≠ elem := by
      have := hm h hn
      simp only [upd, if_true] at this
      exact fun e => this e.symm
    simp [upd, hme, i3 m hm]

namespace MGHeap

theorem upsift_loop_spec : ∀ (fuel : Nat) (st : MGHeap) (elem h : Nat), h < fuel →
    h < st.size → HoleIdx (upd st.heap h elem) st.size st.heap_index h →
    UpOrd (fun k => st.delta (upd st.heap h elem k)) st.size h →
    ∃ st2 h2, upsift_loop fuel st elem h = some (st2, h2) ∧ h2 < st.size ∧
      st2.size = st.size ∧ st2.delta = st.delta ∧
      HoleIdx (upd st2.heap h2 elem) st.size st2.heap_index h2 ∧
      HeapOrd (fun k => st.delta (upd st2.heap h2 elem k)) st.size ∧
      (∀ m, (∀ k, k < st.size → upd st.heap h elem k ≠ m) →
        st2.heap_index m = st.heap_index m) ∧
      (∀ m, (∃ k, k < st.size ∧ upd st2.heap h2 elem k = m) ↔
        (∃ k, k < st.size ∧ upd st.heap h elem k = m))
  | 0, _, _, _, hf, _, _, _ => by omega
  | fuel + 1, st, elem, h, hf, hn, hi, hu => by
    by_cases hc : h ≠ 0 ∧ st.cmp elem (st.heap (PARENT h)) < 0
    · obtain ⟨h0, hlt⟩ := hc
      have hpos : 0 < h := Nat.pos_of_ne_zero h0
      have hp := PARENT_lt hpos
      have hpn : PARENT h < st.size := by omega
      have hne : PARENT h ≠ h := by omega
      have hi2 := HoleIdx_move hi hn hpn hne
      have hkey : st.delta elem < st.delta (st.heap (PARENT h)) := by
        unfold cmp at hlt; omega
      have hu2 : UpOrd (fun k => st.delta
          (upd (upd st.heap h (st.heap (PARENT h))) (PARENT h) elem k)) st.size (PARENT h) := by
        refine UpOrd_step hu hpos hn ?_ ?_ ?_ ?_
        · simpa [upd, hne] using hkey
        · simp [upd]
        · simp [upd, hne, Ne.symm hne]
        · intro k k1 k2
          simp [upd, k1, k2]
      obtain ⟨st2, h2, e, r1, r2, r3, r4, r5, r6, r7⟩ := upsift_loop_spec fuel
        ((st.set_idx (st.heap (PARENT h)) h).set_heap h
          ((st.set_idx (st.heap (PARENT h)) h).heap (PARENT h))) elem (PARENT h)
        (by omega) hpn hi2 hu2
      refine ⟨st2, h2, ?_, r1, r2, r3, r4, r5, ?_, ?_⟩
      · simp only [upsift_loop]
        rw [if_pos ⟨h0, hlt⟩]
        exact e
      · intro m hm
        have hm2 : ∀ k, k < st.size →
            upd (upd st.heap h (st.heap (PARENT h))) (PARENT h) elem k ≠ m := by
          intro k hk
          by_cases k1 : k = PARENT h
          · have := hm h hn
            simpa [upd, k1] using this
          · by_cases k2 : k = h
            · have := hm (PARENT h) hpn
              simpa [upd, k1, k2, hne, Ne.symm hne] using this
            · have := hm k hk
              simpa [upd, k1, k2] using this
        have hmp : m ≠ st.heap (PARENT h) := by
          have := hm (PARENT h) hpn
          simp only [upd, hne, if_false] at this
          exact fun e => this e.symm
        rw [r6 m hm2]
        simp [set_heap, set_idx, upd, hmp]
      · intro m
        refine (r7 m).trans ?_
        show (∃ k, k < st.size ∧
          upd (upd st.heap h (st.heap (PARENT h))) (PARENT h) elem k = m) ↔ _
        constructor
        · rintro ⟨k, hk, e⟩
          by_cases k1 : k = PARENT h
          · exact ⟨h, hn, by simpa [set_heap, set_idx, upd, k1] using e⟩
          · by_cases k2 : k = h
            · exact ⟨PARENT h, hpn, by
                simpa [set_heap, set_idx, upd, k1, k2, hne, Ne.symm hne] using e⟩
            · exact ⟨k, hk, by simpa [set_heap, set_idx, upd, k1, k2] using e⟩
        · rintro ⟨k, hk, e⟩
          by_cases k1 : k = PARENT h
          · exact ⟨h, hn, by
              simpa [set_heap, set_idx, upd, k1, hne, Ne.symm hne] using e⟩
          · by_cases k2 : k = h
            · exact ⟨PARENT h, hpn, by simpa [set_heap, set_idx, upd, k1, k2] using e⟩
            · exact ⟨k, hk, by simpa [set_heap, set_idx, upd, k1, k2] using e⟩
    · refine ⟨st, h, ?_, hn, rfl, rfl, hi, ?_, fun m _ => rfl, fun m => Iff.rfl⟩
      · simp only [upsift_loop]
        rw [if_neg hc]
      · refine UpOrd_done hu ?_
        by_cases h0 : h = 0
        · exact Or.inl h0
        · right
          have : ¬ st.cmp elem (st.heap (PARENT h)) < 0 := fun e => hc ⟨h0, e⟩
          have hne : PARENT h ≠ h := by have := PARENT_lt (Nat.pos_of_ne_zero h0); omega
          unfold cmp at this
          simp only [upd, hne, if_false, if_true]
          omega

end MGHeap
namespace MGHeap

theorem min_lr_some {st : MGHeap} {elem h sm : Nat}
    (e : st.min_lr elem (LEFT h) (RIGHT h) = some sm) :
    (sm = LEFT h ∨ sm = RIGHT h) ∧ sm < st.size ∧ st.delta (st.heap sm) < st.delta elem ∧
    (LEFT h < st.size → st.delta (st.heap sm) ≤ st.delta (st.heap (LEFT h))) ∧
    (RIGHT h < st.size → st.delta (st.heap sm) ≤ st.delta (st.heap (RIGHT h))) := by
  unfold min_lr cmp at e
  dsimp only at e
  by_cases c1 : RIGHT h < st.size ∧ st.delta (st.heap (RIGHT h)) - st.delta (st.heap (LEFT h)) < 0
  · rw [if_pos c1] at e
    by_cases c2 : RIGHT h < st.size ∧ st.delta (st.heap (RIGHT h)) - st.delta elem < 0
    · rw [if_pos c2] at e
      cases e
      exact ⟨Or.inr rfl, c2.1, by omega, fun _ => by omega, fun _ => le_refl _⟩
    · rw [if_neg c2] at e
      cases e
  · rw [if_neg c1] at e
    by_cases c2 : LEFT h < st.size ∧ st.delta (st.heap (LEFT h)) - st.delta elem < 0
    · rw [if_pos c2] at e
      cases e
      refine ⟨Or.inl rfl, c2.1, by omega, fun _ => le_refl _, fun hr => ?_⟩
      have : ¬ st.delta (st.heap (RIGHT h)) - st.delta (st.heap (LEFT h)) < 0 :=
        fun x => c1 ⟨hr, x⟩
      omega
    · rw [if_neg c2] at e
      cases e

theorem min_lr_none {st : MGHeap} {elem h : Nat}
    (e : st.min_lr elem (LEFT h) (RIGHT h) = none) :
    (LEFT h < st.size → st.delta elem ≤ st.delta (st.heap (LEFT h))) ∧
    (RIGHT h < st.size → st.delta elem ≤ st.delta (st.heap (RIGHT h))) := by
  unfold min_lr cmp at e
  dsimp only at e
  have hlr : RIGHT h < st.size → LEFT h < st.size := by
    unfold LEFT RIGHT; omega
  by_cases c1 : RIGHT h < st.size ∧ st.delta (st.heap (RIGHT h)) - st.delta (st.heap (LEFT h)) < 0
  · rw [if_pos c1] at e
    by_cases c2 : RIGHT h < st.size ∧ st.delta (st.heap (RIGHT h)) - st.delta elem < 0
    · rw [if_pos c2] at e
      cases e
    · have : ¬ st.delta (st.heap (RIGHT h)) - st.delta elem < 0 := fun x => c2 ⟨c1.1, x⟩
      exact ⟨fun _ => by omega, fun _ => by omega⟩
  · rw [if_neg c1] at e
    by_cases c2 : LEFT h < st.size ∧ st.delta (st.heap (LEFT h)) - st.delta elem < 0
    · rw [if_pos c2] at e
      cases e
    · refine ⟨fun hl => ?_, fun hr => ?_⟩
      · have : ¬ st.delta (st.heap (LEFT h)) - st.delta elem < 0 := fun x => c2 ⟨hl, x⟩
        omega
      · have a1 : ¬ st.delta (st.heap (LEFT h)) - st.delta elem < 0 := fun x => c2 ⟨hlr hr, x⟩
        have a2 : ¬ st.delta (st.heap (RIGHT h)) - st.delta (st.heap (LEFT h)) < 0 :=
          fun x => c1 ⟨hr, x⟩
        omega

theorem LEFT_ne (h : Nat) : LEFT h ≠ h := by unfold LEFT; omega

theorem RIGHT_ne (h : Nat) : RIGHT h ≠ h := by unfold RIGHT; omega

theorem heapify_loop_spec : ∀ (fuel : Nat) (st : MGHeap) (elem h : Nat),
    st.size - h < fuel → h < st.size →
    HoleIdx (upd st.heap h elem) st.size st.heap_index h →
    DownOrd (fun k => st.delta (upd st.heap h elem k)) st.size h →
    ∃ st2 h2, heapify_loop fuel st elem h (st.min_lr elem (LEFT h) (RIGHT h)) = some (st2, h2) ∧
      h2 < st.size ∧ st2.size = st.size ∧ st2.delta = st.delta ∧
      HoleIdx (upd st2.heap h2 elem) st.size st2.heap_index h2 ∧
      HeapOrd (fun k => st.delta (upd st2.heap h2 elem k)) st.size ∧
      (∀ m, (∀ k, k < st.size → upd st.heap h elem k ≠ m) →
        st2.heap_index m = st.heap_index m) ∧
      (∀ m, (∃ k, k < st.size ∧ upd st2.heap h2 elem k = m) ↔
        (∃ k, k < st.size ∧ upd st.heap h elem k = m))
  | 0, _, _, _, hf, _, _, _ => by omega
  | fuel + 1, st, elem, h, hf, hn, hi, hd => by
    cases hm : st.min_lr elem (LEFT h) (RIGHT h) with
    | none =>
      obtain ⟨hl, hr⟩ := min_lr_none hm
      refine ⟨st, h, rfl, hn, rfl, rfl, hi, ?_, fun m _ => rfl, fun m => Iff.rfl⟩
      refine DownOrd_done hd (fun x => ?_) (fun x => ?_)
      · simpa [upd, LEFT_ne h] using hl x
      · simpa [upd, RIGHT_ne h] using hr x
    | some sm =>
      obtain ⟨hsm, hsn, hlt, hl, hr⟩ := min_lr_some hm
      have hne : sm ≠ h := by
        rcases hsm with e | e
        · rw [e]; exact LEFT_ne h
        · rw [e]; exact RIGHT_ne h
      have hhs : h < sm := by
        rcases hsm with e | e
        · rw [e]; unfold LEFT; omega
        · rw [e]; unfold RIGHT; omega
      have hi2 := HoleIdx_move hi hn hsn hne
      have hd2 : DownOrd (fun k => st.delta
          (upd (upd st.heap h (st.heap sm)) sm elem k)) st.size sm := by
        refine DownOrd_step hd hsm hsn ?_ (fun x => ?_) (fun x => ?_) ?_ ?_ ?_
        · simpa [upd, hne] using hlt
        · simpa [upd, hne, LEFT_ne h] using hl x
        · simpa [upd, hne, RIGHT_ne h] using hr x
        · simp [upd]
        · simp [upd, hne, Ne.symm hne]
        · intro k k1 k2
          simp [upd, k1, k2]
      obtain ⟨st2, h2, e, r1, r2, r3, r4, r5, r6, r7⟩ := heapify_loop_spec fuel
        ((st.set_idx (st.heap sm) h).set_heap h ((st.set_idx (st.heap sm) h).heap sm)) elem sm
        (by show st.size - sm < fuel; omega) hsn hi2 hd2
      refine ⟨st2, h2, ?_, r1, r2, r3, r4, r5, ?_, ?_⟩
      · simp only [heapify_loop]
        exact e
      · intro m hm
        have hm2 : ∀ k, k < st.size → upd (upd st.heap h (st.heap sm)) sm elem k ≠ m := by
          intro k hk
          by_cases k1 : k = sm
          · have := hm h hn
            simpa [upd, k1] using this
          · by_cases k2 : k = h
            · have := hm sm hsn
              simpa [upd, k1, k2, hne, Ne.symm hne] using this
            · have := hm k hk
              simpa [upd, k1, k2] using this
        have hmp : m ≠ st.heap sm := by
          have := hm sm hsn
          simp only [upd, hne, if_false] at this
          exact fun e => this e.symm
        rw [r6 m hm2]
        simp [set_heap, set_idx, upd, hmp]
      · intro m
        refine (r7 m).trans ?_
        show (∃ k, k < st.size ∧ upd (upd st.heap h (st.heap sm)) sm elem k = m) ↔ _
        constructor
        · rintro ⟨k, hk, e⟩
          by_cases k1 : k = sm
          · exact ⟨h, hn, by simpa [upd, k1] using e⟩
          · by_cases k2 : k = h
            · exact ⟨sm, hsn, by simpa [upd, k1, k2, hne, Ne.symm hne] using e⟩
            · exact ⟨k, hk, by simpa [upd, k1, k2] using e⟩
        · rintro ⟨k, hk, e⟩
          by_cases k1 : k = sm
          · exact ⟨h, hn, by simpa [upd, k1, hne, Ne.symm hne] using e⟩
          · by_cases k2 : k = h
            · exact ⟨sm, hsn, by simpa [upd, k1, k2] using e⟩
            · exact ⟨k, hk, by simpa [upd, k1, k2] using e⟩

end MGHeap
namespace MGHeap

theorem upd_heap_self (st : MGHeap) (h : Nat) : upd st.heap h (st.heap h) = st.heap := by
  funext k
  by_cases e : k = h
  · simp [upd, e]
  · simp [upd, e]

theorem Linked.hole {st : MGHeap} (hl : st.Linked) (h : Nat) :
    HoleIdx (upd st.heap h (st.heap h)) st.size st.heap_index h := by
  rw [upd_heap_self]
  exact ⟨hl.inj, fun k hk _ => hl.idx k hk, hl.out⟩

theorem fill_ok {st st2 : MGHeap} {h2 elem : Nat} (hn : h2 < st.size)
    (r2 : st2.size = st.size) (r3 : st2.delta = st.delta)
    (r4 : HoleIdx (upd st2.heap h2 elem) st.size st2.heap_index h2)
    (r5 : HeapOrd (fun k => st.delta (upd st2.heap h2 elem k)) st.size) :
    ((st2.set_idx elem h2).set_heap h2 elem).OK := by
  obtain ⟨f1, f2, f3⟩ := HoleIdx_fill r4 hn
  refine ⟨⟨?_, ?_, ?_⟩, ?_⟩
  · show ∀ a b, a < st2.size → b < st2.size → _
    rw [r2]; exact f1
  · show ∀ n, n < st2.size → _
    rw [r2]; exact f2
  · show ∀ m, (∀ k, k < st2.size → _) → _
    rw [r2]; exact f3
  · show HeapOrd (fun k => st2.delta (upd st2.heap h2 elem k)) st2.size
    rw [r2, r3]; exact r5

/-- Method `upsift` restores the heap when only position `hindex` may be below its
parent. -/
theorem upsift_ok (st : MGHeap) (h : Nat) (hl : st.Linked) (hn : h < st.size)
    (hu : UpOrd (fun k => st.delta (st.heap k)) st.size h) :
    ∃ st2, st.upsift h = some st2 ∧ st2.OK ∧ st2.size = st.size ∧ st2.delta = st.delta ∧
      (∀ m, (∀ k, k < st.size → st.heap k ≠ m) → st2.heap_index m = st.heap_index m) ∧
      (∀ m, (∃ k, k < st.size ∧ st2.heap k = m) ↔ (∃ k, k < st.size ∧ st.heap k = m)) := by
  unfold upsift
  by_cases h0 : h = 0
  · rw [if_pos h0]
    exact ⟨st, rfl, ⟨hl, UpOrd_done hu (Or.inl h0)⟩, rfl, rfl, fun _ _ => rfl, fun _ => Iff.rfl⟩
  · rw [if_neg h0]
    have hu2 : UpOrd (fun k => st.delta (upd st.heap h (st.heap h) k)) st.size h := by
      rw [upd_heap_self]; exact hu
    obtain ⟨st2, h2, e, r1, r2, r3, r4, r5, r6, r7⟩ :=
      upsift_loop_spec (h + 1) st (st.heap h) h (Nat.lt_succ_self _) hn (hl.hole h) hu2
    rw [upd_heap_self] at r6 r7
    dsimp only
    rw [e]
    refine ⟨_, rfl, fill_ok r1 r2 r3 r4 r5, r2, r3, ?_, ?_⟩
    · intro m hm
      have hme : m ≠ st.heap h := fun e => hm h hn e.symm
      show upd st2.heap_index (st.heap h) (h2 : Int) m = _
      rw [← r6 m hm]
      simp [upd, hme]
    · exact r7

/-- Method `heapify` restores the heap when only position `hindex` may be above its
children. -/
theorem heapify_ok (st : MGHeap) (h : Nat) (hl : st.Linked) (hn : h < st.size)
    (hd : DownOrd (fun k => st.delta (st.heap k)) st.size h) :
    ∃ st2, st.heapify h = some st2 ∧ st2.OK ∧ st2.size = st.size ∧ st2.delta = st.delta ∧
      (∀ m, (∀ k, k < st.size → st.heap k ≠ m) → st2.heap_index m = st.heap_index m) ∧
      (∀ m, (∃ k, k < st.size ∧ st2.heap k = m) ↔ (∃ k, k < st.size ∧ st.heap k = m)) := by
  have hd2 : DownOrd (fun k => st.delta (upd st.heap h (st.heap h) k)) st.size h := by
    rw [upd_heap_self]; exact hd
  obtain ⟨st2, h2, e, r1, r2, r3, r4, r5, r6, r7⟩ :=
    heapify_loop_spec (st.size + 1) st (st.heap h) h (by omega) hn (hl.hole h) hd2
  rw [upd_heap_self] at r6 r7
  unfold heapify
  cases hm : st.min_lr (st.heap h) (LEFT h) (RIGHT h) with
  | none =>
    obtain ⟨a1, a2⟩ := min_lr_none hm
    exact ⟨st, rfl, ⟨hl, DownOrd_done hd a1 a2⟩, rfl, rfl, fun _ _ => rfl, fun _ => Iff.rfl⟩
  | some sm =>
    rw [hm] at e
    dsimp only
    rw [e]
    refine ⟨_, rfl, fill_ok r1 r2 r3 r4 r5, r2, r3, ?_, ?_⟩
    · intro m hm
      have hme : m ≠ st.heap h := fun e => hm h hn e.symm
      show upd st2.heap_index (st.heap h) (h2 : Int) m = _
      rw [← r6 m hm]
      simp [upd, hme]
    · exact r7

end MGHeap
namespace MGHeap

theorem Linked.not_in_heap {st : MGHeap} (hl : st.Linked) {m : Nat} (hm : st.heap_index m = -1) :
    ∀ k, k < st.size → st.heap k ≠ m := by
  intro k hk e
  have := hl.idx k hk
  rw [e, hm] at this
  omega

theorem OK.is_heap {st : MGHeap} (h : st.OK) : st.is_heap := by
  refine ⟨h.linked.idx, fun n _ => ⟨fun hl => ?_, fun hr => ?_⟩⟩
  · have := h.ord (LEFT n) (by unfold LEFT; omega) hl
    simp only [PARENT_LEFT] at this
    unfold cmp; omega
  · have := h.ord (RIGHT n) (by unfold RIGHT; omega) hr
    simp only [PARENT_RIGHT] at this
    unfold cmp; omega

theorem empty_ok (delta : Nat → Int) : (empty delta).OK :=
  ⟨⟨(fun a b ha => by cases ha), (fun n hn => by cases hn), (fun _ _ => rfl)⟩,
    (fun k _ hk => by cases hk)⟩

theorem reset_loop_spec (st : MGHeap) : ∀ k,
    (st.reset_loop k).heap = st.heap ∧ (st.reset_loop k).size = st.size ∧
    (st.reset_loop k).delta = st.delta ∧
    ∀ m, (st.reset_loop k).heap_index m =
      if ∃ j, j < k ∧ st.heap j = m then -1 else st.heap_index m
  | 0 => ⟨rfl, rfl, rfl, fun m => by simp [reset_loop]⟩
  | k + 1 => by
    obtain ⟨a1, a2, a3, a4⟩ := reset_loop_spec st k
    refine ⟨a1, a2, a3, fun m => ?_⟩
    show upd (st.reset_loop k).heap_index (st.heap k) (-1) m = _
    by_cases e : m = st.heap k
    · have : ∃ j, j < k + 1 ∧ st.heap j = m := ⟨k, Nat.lt_succ_self _, e.symm⟩
      rw [if_pos this]
      simp [upd, e]
    · simp only [upd, e, if_false]
      rw [a4 m]
      by_cases c : ∃ j, j < k ∧ st.heap j = m
      · obtain ⟨j, hj, hjm⟩ := c
        rw [if_pos ⟨j, hj, hjm⟩, if_pos ⟨j, by omega, hjm⟩]
      · have c2 : ¬ ∃ j, j < k + 1 ∧ st.heap j = m := by
          rintro ⟨j, hj, hjm⟩
          by_cases hjk : j = k
          · exact e (by rw [← hjm, hjk])
          · exact c ⟨j, by omega, hjm⟩
        rw [if_neg c, if_neg c2]

/-- Method `reset`: the heap is empty and every generator carries heap index -1. -/
theorem reset_ok (st : MGHeap) (h : st.OK) :
    st.reset.OK ∧ st.reset.size = 0 ∧ ∀ m, st.reset.heap_index m = -1 := by
  obtain ⟨_, _, _, a4⟩ := reset_loop_spec st st.size
  have hall : ∀ m, st.reset.heap_index m = -1 := by
    intro m
    show (st.reset_loop st.size).heap_index m = -1
    rw [a4 m]
    by_cases c : ∃ j, j < st.size ∧ st.heap j = m
    · rw [if_pos c]
    · rw [if_neg c]
      exact h.linked.out m (fun k hk e => c ⟨k, hk, e⟩)
  exact ⟨⟨⟨(fun a b ha => by cases ha), (fun n hn => by cases hn), (fun m _ => hall m)⟩,
    (fun k _ hk => by cases hk)⟩, rfl, hall⟩

/-- Method `insert` of a generator that is not in the heap. -/
theorem insert_ok (st : MGHeap) (elem : Nat) (h : st.OK) (he : st.heap_index elem = -1) :
    ∃ st2, st.insert elem = some st2 ∧ st2.OK ∧ st2.size = st.size + 1 ∧
      st2.delta = st.delta ∧ (∃ k, k < st2.size ∧ st2.heap k = elem) ∧
      (∀ m, m ≠ elem → st.heap_index m = -1 → st2.heap_index m = -1) := by
  have hne := h.linked.not_in_heap he
  have hl : ((st.set_idx elem st.size).emplace_back elem).Linked := by
    refine ⟨fun a b ha hb hab => ?_, fun n hn => ?_, fun m hm => ?_⟩
    · have ha2 : a < st.size + 1 := ha
      have hb2 : b < st.size + 1 := hb
      have hab2 : upd st.heap st.size elem a = upd st.heap st.size elem b := hab
      by_cases a1 : a = st.size <;> by_cases b1 : b = st.size
      · omega
      · simp only [upd, a1, b1, if_true, if_false] at hab2
        exact absurd hab2.symm (hne b (by omega))
      · simp only [upd, a1, b1, if_true, if_false] at hab2
        exact absurd hab2 (hne a (by omega))
      · simp only [upd, a1, b1, if_false] at hab2
        exact h.linked.inj a b (by omega) (by omega) hab2
    · have hn2 : n < st.size + 1 := hn
      show upd st.heap_index elem (st.size : Int) (upd st.heap st.size elem n) = n
      by_cases n1 : n = st.size
      · simp [upd, n1]
      · have := hne n (by omega)
        simp only [upd, n1, if_false, this]
        exact h.linked.idx n (by omega)
    · have hm2 : ∀ k, k < st.size + 1 → upd st.heap st.size elem k ≠ m := hm
      show upd st.heap_index elem (st.size : Int) m = -1
      have hme : m ≠ elem := by
        have := hm2 st.size (Nat.lt_succ_self _)
        simp only [upd, if_true] at this
        exact fun e => this e.symm
      simp only [upd, hme, if_false]
      refine h.linked.out m (fun k hk => ?_)
      have := hm2 k (by omega)
      have hk2 : k ≠ st.size := by omega
      simpa [upd, hk2] using this
  have hu : UpOrd (fun k => st.delta (upd st.heap st.size elem k)) (st.size + 1) st.size := by
    refine ⟨fun k k0 kn hk => ?_, fun c c0 cn hc _ => ?_⟩
    · have hp := PARENT_lt k0
      have e1 : PARENT k ≠ st.size := by omega
      simp only [upd, hk, e1, if_false]
      exact h.ord k k0 (by omega)
    · have hp := PARENT_lt c0
      omega
  obtain ⟨st2, e, r1, r2, r3, r4, r5⟩ := upsift_ok _ st.size hl (Nat.lt_succ_self _) hu
  refine ⟨st2, e, r1, r2, r3, ?_, ?_⟩
  · have := (r5 elem).2 ⟨st.size, Nat.lt_succ_self _, by simp [emplace_back, set_idx, upd]⟩
    obtain ⟨k, hk, hk2⟩ := this
    exact ⟨k, by rw [r2]; exact hk, hk2⟩
  · intro m hme hm
    have hm3 := h.linked.not_in_heap hm
    rw [r4 m (fun k hk => ?_)]
    · show upd st.heap_index elem (st.size : Int) m = -1
      simp [upd, hme, hm]
    · have hk1 : k < st.size + 1 := hk
      show upd st.heap st.size elem k ≠ m
      by_cases k1 : k = st.size
      · simp only [upd, k1, if_true]
        exact fun e => hme e.symm
      · simp only [upd, k1, if_false]
        exact hm3 k (by omega)

end MGHeap
namespace MGHeap

/-- Method `replace`, on a heap that neither holds `elem` nor counts it among the generators
out of the heap (`remove` calls it so, with the last element just popped). -/
theorem replace_ok (st : MGHeap) (h elem : Nat)
    (hinj : ∀ a b, a < st.size → b < st.size → st.heap a = st.heap b → a = b)
    (hidx : ∀ n, n < st.size → st.heap_index (st.heap n) = n)
    (hout : ∀ m, m ≠ elem → (∀ k, k < st.size → st.heap k ≠ m) → st.heap_index m = -1)
    (hel : ∀ k, k < st.size → st.heap k ≠ elem)
    (hord : HeapOrd (fun k => st.delta (st.heap k)) st.size) (hn : h < st.size) :
    ∃ st2, st.replace h elem = some st2 ∧ st2.OK ∧ st2.size = st.size ∧
      st2.delta = st.delta ∧ st2.heap_index (st.heap h) = -1 ∧
      (∀ m, m ≠ elem → st.heap_index m = -1 → st2.heap_index m = -1) := by
  have hoe : st.heap h ≠ elem := hel h hn
  have hl : (((st.set_idx (st.heap h) (-1)).set_idx elem h).set_heap h elem).Linked := by
    refine ⟨fun a b ha hb hab => ?_, fun n hn2 => ?_, fun m hm => ?_⟩
    · have ha2 : a < st.size := ha
      have hb2 : b < st.size := hb
      have hab2 : upd st.heap h elem a = upd st.heap h elem b := hab
      by_cases a1 : a = h <;> by_cases b1 : b = h
      · omega
      · simp only [upd, a1, b1, if_true, if_false] at hab2
        exact absurd hab2.symm (hel b hb2)
      · simp only [upd, a1, b1, if_true, if_false] at hab2
        exact absurd hab2 (hel a ha2)
      · simp only [upd, a1, b1, if_false] at hab2
        exact hinj a b ha2 hb2 hab2
    · have hn3 : n < st.size := hn2
      show upd (upd st.heap_index (st.heap h) (-1)) elem (h : Int) (upd st.heap h elem n) = n
      by_cases n1 : n = h
      · simp [upd, n1]
      · have e1 := hel n hn3
        have e2 : st.heap n ≠ st.heap h := fun e => n1 (hinj n h hn3 hn e)
        simp only [upd, n1, if_false, e1, e2]
        exact hidx n hn3
    · have hm2 : ∀ k, k < st.size → upd st.heap h elem k ≠ m := hm
      show upd (upd st.heap_index (st.heap h) (-1)) elem (h : Int) m = -1
      have hme : m ≠ elem := by
        have := hm2 h hn
        simp only [upd, if_true] at this
        exact fun e => this e.symm
      by_cases hmo : m = st.heap h
      · simp [upd, hmo, hoe]
      · simp only [upd, hme, hmo, if_false]
        refine hout m hme (fun k hk => ?_)
        by_cases k1 : k = h
        · rw [k1]; exact fun e => hmo e.symm
        · have := hm2 k hk
          simpa [upd, k1] using this
  have hkey : ∀ k, k < st.size → k ≠ h → (fun k => st.delta (upd st.heap h elem k)) k =
      (fun k => st.delta (st.heap k)) k := by
    intro k _ hk
    simp [upd, hk]
  have hfin : ∀ st2 : MGHeap, st2.OK →
      st2.size = (((st.set_idx (st.heap h) (-1)).set_idx elem h).set_heap h elem).size →
      st2.delta = (((st.set_idx (st.heap h) (-1)).set_idx elem h).set_heap h elem).delta →
      (∀ m, (∀ k, k < st.size → upd st.heap h elem k ≠ m) → st2.heap_index m =
        upd (upd st.heap_index (st.heap h) (-1)) elem (h : Int) m) →
      st2.OK ∧ st2.size = st.size ∧ st2.delta = st.delta ∧
      st2.heap_index (st.heap h) = -1 ∧
      (∀ m, m ≠ elem → st.heap_index m = -1 → st2.heap_index m = -1) := by
    intro st2 r1 r2 r3 r4
    have hold : ∀ k, k < st.size → upd st.heap h elem k ≠ st.heap h := by
      intro k hk
      by_cases k1 : k = h
      · simp only [upd, k1, if_true]; exact fun e => hoe e.symm
      · simp only [upd, k1, if_false]; exact fun e => k1 (hinj k h hk hn e)
    refine ⟨r1, r2, r3, ?_, ?_⟩
    · rw [r4 _ hold]
      simp [upd, hoe]
    · intro m hme hm
      have hnot : ∀ k, k < st.size → st.heap k ≠ m := by
        intro k hk e
        have := hidx k hk
        rw [e, hm] at this
        omega
      rw [r4 m (fun k hk => ?_)]
      · by_cases hmo : m = st.heap h
        · simp [upd, hmo, hoe]
        · simp [upd, hme, hmo, hm]
      · by_cases k1 : k = h
        · simp only [upd, k1, if_true]; exact fun e => hme e.symm
        · simp only [upd, k1, if_false]; exact hnot k hk
  unfold replace
  dsimp only
  by_cases c1 : st.cmp (st.heap h) elem > 0
  · rw [if_pos c1]
    have hu : UpOrd (fun k => (((st.set_idx (st.heap h) (-1)).set_idx elem h).set_heap h
        elem).delta ((((st.set_idx (st.heap h) (-1)).set_idx elem h).set_heap h elem).heap k))
        (((st.set_idx (st.heap h) (-1)).set_idx elem h).set_heap h elem).size h := by
      refine UpOrd_of_change hord hkey ?_
      show st.delta (upd st.heap h elem h) ≤ st.delta (st.heap h)
      unfold cmp at c1
      simp only [upd, if_true]
      omega
    obtain ⟨st2, e, r1, r2, r3, r4, _⟩ := upsift_ok _ h hl hn hu
    exact ⟨st2, e, hfin st2 r1 r2 r3 r4⟩
  · rw [if_neg c1]
    by_cases c2 : st.cmp (st.heap h) elem < 0
    · rw [if_pos c2]
      have hd : DownOrd (fun k => (((st.set_idx (st.heap h) (-1)).set_idx elem h).set_heap h
          elem).delta ((((st.set_idx (st.heap h) (-1)).set_idx elem h).set_heap h elem).heap k))
          (((st.set_idx (st.heap h) (-1)).set_idx elem h).set_heap h elem).size h := by
        refine DownOrd_of_change hord hkey ?_
        show st.delta (st.heap h) ≤ st.delta (upd st.heap h elem h)
        unfold cmp at c2
        simp only [upd, if_true]
        omega
      obtain ⟨st2, e, r1, r2, r3, r4, _⟩ := heapify_ok _ h hl hn hd
      exact ⟨st2, e, hfin st2 r1 r2 r3 r4⟩
    · rw [if_neg c2]
      refine ⟨_, rfl, hfin _ ⟨hl, ?_⟩ rfl rfl (fun m _ => rfl)⟩
      have he : st.delta elem = st.delta (st.heap h) := by
        unfold cmp at c1 c2; omega
      intro k k0 kn
      have hk : st.delta (st.heap (PARENT k)) ≤ st.delta (st.heap k) := hord k k0 kn
      show st.delta (upd st.heap h elem (PARENT k)) ≤ st.delta (upd st.heap h elem k)
      by_cases k1 : k = h
      · have k2 : PARENT k ≠ h := by have := PARENT_lt k0; omega
        simp only [upd, k1, k2, if_true, if_false, he]
        rw [k1] at hk k2
        simp only [k2, if_false]
        exact hk
      · by_cases k2 : PARENT k = h
        · simp only [upd, k1, k2, if_true, if_false, he]
          rw [k2] at hk; exact hk
        · simp only [upd, k1, k2, if_false]
          exact hk

/-- Method `remove` of the generator at a position of the heap. -/
theorem remove_ok (st : MGHeap) (i : Nat) (h : st.OK) (hi : i < st.size) :
    ∃ st2, st.remove i = some st2 ∧ st2.OK ∧ st2.size = st.size - 1 ∧
      st2.delta = st.delta ∧ st2.heap_index (st.heap i) = -1 ∧
      (∀ m, st.heap_index m = -1 → st2.heap_index m = -1) := by
  unfold remove
  by_cases c : (i : Int) < (st.size : Int) - 1
  · rw [if_pos c]
    have hi2 : i < st.size - 1 := by omega
    have hlast : st.size - 1 < st.size := by omega
    obtain ⟨st2, e, r1, r2, r3, r4, r5⟩ := replace_ok st.pop_back i (st.heap (st.size - 1))
      (fun a b ha hb hab => h.linked.inj a b
        (by have : a < st.size - 1 := ha; omega) (by have : b < st.size - 1 := hb; omega) hab)
      (fun n hn => h.linked.idx n (by have : n < st.size - 1 := hn; omega))
      (fun m hm hk => h.linked.out m (fun k hk2 => by
        by_cases k1 : k = st.size - 1
        · rw [k1]; exact fun e => hm e.symm
        · exact hk k (by show k < st.size - 1; omega)))
      (fun k hk e => by
        have : k < st.size - 1 := hk
        have := h.linked.inj k (st.size - 1) (by omega) hlast e
        omega)
      (fun k k0 kn => h.ord k k0 (by have : k < st.size - 1 := kn; omega)) hi2
    refine ⟨st2, e, r1, r2, r3, r4, fun m hm => ?_⟩
    refine r5 m (fun e => ?_) hm
    have := h.linked.idx (st.size - 1) hlast
    rw [← e, hm] at this
    omega
  · rw [if_neg c]
    have hi2 : i = st.size - 1 := by omega
    refine ⟨_, rfl, ⟨⟨fun a b ha hb hab => ?_, fun n hn => ?_, fun m hm => ?_⟩, ?_⟩, rfl, rfl,
      by simp [pop_back, set_idx, upd], fun m hm => ?_⟩
    · have ha2 : a < st.size - 1 := ha
      have hb2 : b < st.size - 1 := hb
      exact h.linked.inj a b (by omega) (by omega) hab
    · have hn2 : n < st.size - 1 := hn
      show upd st.heap_index (st.heap i) (-1) (st.heap n) = n
      have : st.heap n ≠ st.heap i := fun e => by
        have := h.linked.inj n i (by omega) hi e
        omega
      simp only [upd, this, if_false]
      exact h.linked.idx n (by omega)
    · have hm2 : ∀ k, k < st.size - 1 → st.heap k ≠ m := hm
      show upd st.heap_index (st.heap i) (-1) m = -1
      by_cases hmi : m = st.heap i
      · simp [upd, hmi]
      · simp only [upd, hmi, if_false]
        refine h.linked.out m (fun k hk => ?_)
        by_cases k1 : k = i
        · rw [k1]; exact fun e => hmi e.symm
        · exact hm2 k (by omega)
    · intro k k0 kn
      have kn2 : k < st.size - 1 := kn
      exact h.ord k k0 (by omega)
    · show upd st.heap_index (st.heap i) (-1) m = -1
      by_cases hmi : m = st.heap i
      · simp [upd, hmi]
      · simp [upd, hmi, hm]

end MGHeap
namespace MGHeap

/-- Method `get` on a heap that is not empty. -/
theorem get_ok (st : MGHeap) (h : st.OK) (hn : 0 < st.size) :
    ∃ st2, st.get = some (st.heap 0, st2) ∧ st2.OK ∧ st2.size = st.size - 1 ∧
      st2.delta = st.delta ∧ st2.heap_index (st.heap 0) = -1 ∧
      (∀ m, st.heap_index m = -1 → st2.heap_index m = -1) := by
  unfold get
  dsimp only
  by_cases c : (st.set_idx (st.heap 0) (-1)).size = 1
  · rw [if_pos c]
    have c2 : st.size = 1 := c
    have hall : ∀ m, upd st.heap_index (st.heap 0) (-1) m = -1 := by
      intro m
      by_cases hm : m = st.heap 0
      · simp [upd, hm]
      · simp only [upd, hm, if_false]
        refine h.linked.out m (fun k hk => ?_)
        have : k = 0 := by omega
        rw [this]; exact fun e => hm e.symm
    refine ⟨_, rfl, ⟨⟨fun a b ha => ?_, fun n hn2 => ?_, fun m _ => hall m⟩, fun k _ hk => ?_⟩,
      by show st.size - 1 = st.size - 1; rfl, rfl, hall _, fun m _ => hall m⟩
    · have : a < st.size - 1 := ha
      omega
    · have : n < st.size - 1 := hn2
      omega
    · have : k < st.size - 1 := hk
      omega
  · rw [if_neg c]
    have c2 : st.size ≠ 1 := c
    have hlast : st.size - 1 < st.size := by omega
    have hl0 : st.heap (st.size - 1) ≠ st.heap 0 := fun e => by
      have := h.linked.inj _ _ hlast hn e
      omega
    have hl : (((st.set_idx (st.heap 0) (-1)).set_idx
        ((st.set_idx (st.heap 0) (-1)).heap ((st.set_idx (st.heap 0) (-1)).size - 1)) 0).set_heap 0
        (((st.set_idx (st.heap 0) (-1)).set_idx
          ((st.set_idx (st.heap 0) (-1)).heap ((st.set_idx (st.heap 0) (-1)).size - 1)) 0).heap
          (((st.set_idx (st.heap 0) (-1)).set_idx
            ((st.set_idx (st.heap 0) (-1)).heap ((st.set_idx (st.heap 0) (-1)).size - 1)) 0).size
              - 1))).pop_back.Linked := by
      refine ⟨fun a b ha hb hab => ?_, fun n hn2 => ?_, fun m hm => ?_⟩
      · have ha2 : a < st.size - 1 := ha
        have hb2 : b < st.size - 1 := hb
        have hab2 : upd st.heap 0 (st.heap (st.size - 1)) a =
          upd st.heap 0 (st.heap (st.size - 1)) b := hab
        by_cases a1 : a = 0 <;> by_cases b1 : b = 0
        · omega
        · simp only [upd, a1, b1, if_true, if_false] at hab2
          have := h.linked.inj _ _ hlast (by omega) hab2
          omega
        · simp only [upd, a1, b1, if_true, if_false] at hab2
          have := h.linked.inj _ _ (by omega) hlast hab2
          omega
        · simp only [upd, a1, b1, if_false] at hab2
          exact h.linked.inj a b (by omega) (by omega) hab2
      · have hn3 : n < st.size - 1 := hn2
        show upd (upd st.heap_index (st.heap 0) (-1)) (st.heap (st.size - 1)) 0
          (upd st.heap 0 (st.heap (st.size - 1)) n) = n
        by_cases n1 : n = 0
        · simp [upd, n1]
        · have e1 : st.heap n ≠ st.heap (st.size - 1) := fun e => by
            have := h.linked.inj _ _ (by omega) hlast e
            omega
          have e2 : st.heap n ≠ st.heap 0 := fun e => n1 (h.linked.inj _ _ (by omega) hn e)
          simp only [upd, n1, if_false, e1, e2]
          exact h.linked.idx n (by omega)
      · have hm2 : ∀ k, k < st.size - 1 → upd st.heap 0 (st.heap (st.size - 1)) k ≠ m := hm
        show upd (upd st.heap_index (st.heap 0) (-1)) (st.heap (st.size - 1)) 0 m = -1
        have hml : m ≠ st.heap (st.size - 1) := by
          have := hm2 0 (by omega)
          simp only [upd, if_true] at this
          exact fun e => this e.symm
        by_cases hm0 : m = st.heap 0
        · simp [upd, hm0, Ne.symm hl0]
        · simp only [upd, hml, hm0, if_false]
          refine h.linked.out m (fun k hk => ?_)
          by_cases k0 : k = 0
          · rw [k0]; exact fun e => hm0 e.symm
          · by_cases k1 : k = st.size - 1
            · rw [k1]; exact fun e => hml e.symm
            · have := hm2 k (by omega)
              simpa [upd, k0] using this
    have hd : DownOrd (fun k => st.delta (upd st.heap 0 (st.heap (st.size - 1)) k))
        (st.size - 1) 0 := by
      refine ⟨fun k k0 kn hk => ?_, fun c c0 cn hc h0 => by omega⟩
      have k1 : k ≠ 0 := by omega
      simp only [upd, k1, hk, if_false]
      exact h.ord k k0 (by omega)
    obtain ⟨st2, e, r1, r2, r3, r4, _⟩ := heapify_ok _ 0 hl (by show 0 < st.size - 1; omega) hd
    rw [e]
    refine ⟨st2, rfl, r1, r2, r3, ?_, fun m hm => ?_⟩
    · rw [r4 _ (fun k hk => ?_)]
      · show upd (upd st.heap_index (st.heap 0) (-1)) (st.heap (st.size - 1)) 0 (st.heap 0) = -1
        simp [upd, Ne.symm hl0]
      · have hk2 : k < st.size - 1 := hk
        show upd st.heap 0 (st.heap (st.size - 1)) k ≠ st.heap 0
        by_cases k0 : k = 0
        · simp only [upd, k0, if_true]; exact hl0
        · simp only [upd, k0, if_false]
          exact fun e => k0 (h.linked.inj _ _ (by omega) hn e)
    · have hnot := h.linked.not_in_heap hm
      rw [r4 m (fun k hk => ?_)]
      · show upd (upd st.heap_index (st.heap 0) (-1)) (st.heap (st.size - 1)) 0 m = -1
        have e1 : m ≠ st.heap (st.size - 1) := fun e => hnot _ hlast e.symm
        have e2 : m ≠ st.heap 0 := fun e => hnot _ hn e.symm
        simp [upd, e1, e2, hm]
      · have hk2 : k < st.size - 1 := hk
        show upd st.heap 0 (st.heap (st.size - 1)) k ≠ m
        by_cases k0 : k = 0
        · simp only [upd, k0, if_true]; exact hnot _ hlast
        · simp only [upd, k0, if_false]; exact hnot k (by omega)

/-- Method `change_value` at a position of the heap. -/
theorem change_value_ok (st : MGHeap) (i : Nat) (value : Int) (h : st.OK) (hi : i < st.size) :
    ∃ st2, st.change_value i value = some st2 ∧ st2.OK ∧ st2.size = st.size ∧
      st2.delta = upd st.delta (st.heap i) value ∧
      (∀ m, st.heap_index m = -1 → st2.heap_index m = -1) := by
  have hl : (st.set_delta (st.heap i) value).Linked :=
    ⟨h.linked.inj, h.linked.idx, h.linked.out⟩
  have hkey : ∀ k, k < st.size → k ≠ i →
      (fun k => upd st.delta (st.heap i) value (st.heap k)) k =
      (fun k => st.delta (st.heap k)) k := by
    intro k hkn hk
    have : st.heap k ≠ st.heap i := fun e => hk (h.linked.inj k i hkn hi e)
    simp [upd, this]
  have hfin : ∀ st2 : MGHeap, st2.OK →
      st2.size = st.size → st2.delta = upd st.delta (st.heap i) value →
      (∀ m, (∀ k, k < st.size → st.heap k ≠ m) → st2.heap_index m = st.heap_index m) →
      st2.OK ∧ st2.size = st.size ∧ st2.delta = upd st.delta (st.heap i) value ∧
      (∀ m, st.heap_index m = -1 → st2.heap_index m = -1) := by
    intro st2 r1 r2 r3 r4
    refine ⟨r1, r2, r3, fun m hm => ?_⟩
    rw [r4 m (h.linked.not_in_heap hm)]
    exact hm
  unfold change_value update updt
  dsimp only
  by_cases c1 : st.delta (st.heap i) - value > 0
  · rw [if_pos c1]
    have hu : UpOrd (fun k => (st.set_delta (st.heap i) value).delta
        ((st.set_delta (st.heap i) value).heap k)) (st.set_delta (st.heap i) value).size i := by
      refine UpOrd_of_change h.ord hkey ?_
      show upd st.delta (st.heap i) value (st.heap i) ≤ st.delta (st.heap i)
      simp only [upd, if_true]
      omega
    obtain ⟨st2, e, r1, r2, r3, r4, _⟩ := upsift_ok _ i hl hi hu
    exact ⟨st2, e, hfin st2 r1 r2 r3 r4⟩
  · rw [if_neg c1]
    by_cases c2 : st.delta (st.heap i) - value < 0
    · rw [if_pos c2]
      have hd : DownOrd (fun k => (st.set_delta (st.heap i) value).delta
          ((st.set_delta (st.heap i) value).heap k)) (st.set_delta (st.heap i) value).size i := by
        refine DownOrd_of_change h.ord hkey ?_
        show st.delta (st.heap i) ≤ upd st.delta (st.heap i) value (st.heap i)
        simp only [upd, if_true]
        omega
      obtain ⟨st2, e, r1, r2, r3, r4, _⟩ := heapify_ok _ i hl hi hd
      exact ⟨st2, e, hfin st2 r1 r2 r3 r4⟩
    · rw [if_neg c2]
      refine ⟨_, rfl, hfin _ ⟨hl, ?_⟩ rfl rfl (fun m _ => rfl)⟩
      have he : value = st.delta (st.heap i) := by omega
      intro k k0 kn
      have hk : st.delta (st.heap (PARENT k)) ≤ st.delta (st.heap k) := h.ord k k0 kn
      show upd st.delta (st.heap i) value (st.heap (PARENT k)) ≤
        upd st.delta (st.heap i) value (st.heap k)
      have hsame : ∀ m, upd st.delta (st.heap i) value m = st.delta m := by
        intro m
        by_cases hm : m = st.heap i
        · simp [upd, hm, he]
        · simp [upd, hm]
      rw [hsame, hsame]
      exact hk

/-- The client assigns the delta of a generator that is not in the heap. -/
theorem set_delta_ok (st : MGHeap) (mg : Nat) (value : Int) (h : st.OK)
    (hm : st.heap_index mg = -1) : (st.set_delta mg value).OK := by
  refine ⟨⟨h.linked.inj, h.linked.idx, h.linked.out⟩, fun k k0 kn => ?_⟩
  have hnot := h.linked.not_in_heap hm
  have hp : PARENT k < st.size := by
    have := PARENT_lt k0
    have : k < st.size := kn
    omega
  show upd st.delta mg value (st.heap (PARENT k)) ≤ upd st.delta mg value (st.heap k)
  simp only [upd, hnot k kn, hnot _ hp, if_false]
  exact h.ord k k0 kn

end MGHeap

/-- Every state reached from the empty heap by valid calls satisfies the invariant. -/
theorem HeapReach.ok {delta : Nat → Int} {st : MGHeap} (h : HeapReach delta st) : st.OK := by
  induction h with
  | init => exact MGHeap.empty_ok delta
  | step c _ hv e ih =>
    cases c with
    | reset =>
      simp only [MGHeap.call, Option.some.injEq] at e
      rw [← e]
      exact (MGHeap.reset_ok _ ih).1
    | insert mg =>
      obtain ⟨st3, e3, r, _⟩ := MGHeap.insert_ok _ mg ih hv
      have : st3 = _ := Option.some.inj (e3.symm.trans e)
      rw [← this]; exact r
    | get =>
      obtain ⟨st3, e3, r, _⟩ := MGHeap.get_ok _ ih hv
      simp only [MGHeap.call, e3, Option.map_some', Option.some.injEq] at e
      rw [← e]; exact r
    | remove i =>
      obtain ⟨st3, e3, r, _⟩ := MGHeap.remove_ok _ i ih hv
      have : st3 = _ := Option.some.inj (e3.symm.trans e)
      rw [← this]; exact r
    | change_value i v =>
      obtain ⟨st3, e3, r, _⟩ := MGHeap.change_value_ok _ i v ih hv
      have : st3 = _ := Option.some.inj (e3.symm.trans e)
      rw [← this]; exact r
  | set_delta mg value _ hm ih => exact MGHeap.set_delta_ok _ mg value ih hm
/-! ## The constructor of `MoveGenerators` -/

namespace MoveGenerators

theorem insert_pair_fields (mg : MoveGenerators) (c a b : Int) :
    (mg.insert_pair c a b).moves = mg.moves ++ [(a, b), (b, a)] ∧
    (mg.insert_pair c a b).edge_costs = mg.edge_costs ++ [c] ∧
    (mg.insert_pair c a b).max_num_neighbors = mg.max_num_neighbors ∧
    (a ≠ b → ∀ v, (mg.insert_pair c a b).base_move_indices_involving v =
      if v = a ∨ v = b then mg.base_move_indices_involving v ++ [mg.moves.length]
      else mg.base_move_indices_involving v) := by
  refine ⟨rfl, rfl, rfl, fun hab v => ?_⟩
  simp only [insert_pair, set_base, push_moves, upd]
  by_cases h1 : v = b
  · have : b ≠ a := fun e => hab e.symm
    simp [h1, this]
  · by_cases h2 : v = a
    · simp [h2, hab]
    · simp [h1, h2]

theorem getElem?_two_append {α : Type} (l : List α) (x y : α) (k : Nat) :
    (l ++ [x, y])[k]? =
      if k < l.length then l[k]? else if k = l.length then some x
      else if k = l.length + 1 then some y else none := by
  by_cases h1 : k < l.length
  · rw [if_pos h1, List.getElem?_append_left h1]
  · rw [if_neg h1, List.getElem?_append_right (by omega)]
    by_cases h2 : k = l.length
    · simp [h2]
    · rw [if_neg h2]
      by_cases h3 : k = l.length + 1
      · simp [h3]
      · rw [if_neg h3]
        have : 2 ≤ k - l.length := by omega
        exact List.getElem?_eq_none (by simpa using this)

end MoveGenerators

/-- A new pair is inserted for the position `(i, p)` that is processed. -/
theorem PairsInv.insert_new {nb : Int → List Int} {mg : MoveGenerators} {D D2 : Int → Nat → Prop}
    (h : PairsInv nb mg D) (c : Int) {a b i : Int} {p : Nat} (hab : a < b)
    (hnew : ¬ ∃ m, mg.moves[2 * m]? = some (a, b))
    (hD : ∀ x q, D2 x q ↔ (D x q ∨ (x = i ∧ q = p)))
    (hij : (i = a ∧ (nb i).getD p 0 = b) ∨ (i = b ∧ (nb i).getD p 0 = a)) :
    PairsInv nb (mg.insert_pair c a b) D2 := by
  obtain ⟨f1, f2, _, f4⟩ := MoveGenerators.insert_pair_fields mg c a b
  have hne : a ≠ b := ne_of_lt hab
  have f4 := f4 hne
  have hlen := h.len
  -- the moves at even indices after the insertion
  have hget : ∀ m, (mg.insert_pair c a b).moves[2 * m]? =
      if m < mg.edge_costs.length then mg.moves[2 * m]? else
        if m = mg.edge_costs.length then some (a, b) else none := by
    intro m
    rw [f1, MoveGenerators.getElem?_two_append]
    by_cases h1 : m < mg.edge_costs.length
    · rw [if_pos (by omega), if_pos h1]
    · rw [if_neg (by omega), if_neg h1]
      by_cases h2 : m = mg.edge_costs.length
      · rw [if_pos (by omega), if_pos h2]
      · rw [if_neg (by omega), if_neg (by omega), if_neg h2]
  have hold : ∀ m x, mg.moves[2 * m]? = some x → m < mg.edge_costs.length := by
    intro m x e
    have := (List.getElem?_eq_some.1 e).1
    omega
  have hget2 : ∀ m x, (mg.insert_pair c a b).moves[2 * m]? = some x ↔
      (mg.moves[2 * m]? = some x ∨ (m = mg.edge_costs.length ∧ x = (a, b))) := by
    intro m x
    rw [hget m]
    by_cases h1 : m < mg.edge_costs.length
    · rw [if_pos h1]
      constructor
      · exact fun e => Or.inl e
      · rintro (e | ⟨e, _⟩)
        · exact e
        · omega
    · rw [if_neg h1]
      by_cases h2 : m = mg.edge_costs.length
      · rw [if_pos h2]
        constructor
        · intro e
          exact Or.inr ⟨h2, (Option.some.inj e).symm⟩
        · rintro (e | ⟨_, e⟩)
          · exact absurd (hold m x e) h1
          · rw [e]
      · rw [if_neg h2]
        constructor
        · intro e; cases e
        · rintro (e | ⟨e, _⟩)
          · exact absurd (hold m x e) h1
          · exact absurd e h2
  refine ⟨?_, ?_, ?_, ?_, ?_, ?_⟩
  · rw [f1, f2]
    simp only [List.length_append, List.length_cons, List.length_nil]
    omega
  · intro m hm
    rw [f2] at hm
    simp only [List.length_append, List.length_cons, List.length_nil] at hm
    by_cases h1 : m < mg.edge_costs.length
    · obtain ⟨x, y, hxy, e1, e2⟩ := h.shape m h1
      refine ⟨x, y, hxy, (hget2 m _).2 (Or.inl e1), ?_⟩
      rw [f1, MoveGenerators.getElem?_two_append, if_pos (by omega)]
      exact e2
    · have h2 : m = mg.edge_costs.length := by omega
      refine ⟨a, b, hab, (hget2 m _).2 (Or.inr ⟨h2, rfl⟩), ?_⟩
      rw [f1, MoveGenerators.getElem?_two_append, if_neg (by omega), if_neg (by omega),
        if_pos (by omega)]
  · intro v idx
    rw [f4 v]
    constructor
    · intro hin
      by_cases hv : v = a ∨ v = b
      · rw [if_pos hv] at hin
        rcases List.mem_append.1 hin with e | e
        · obtain ⟨m, x, y, e1, e2, e3⟩ := (h.base_iff v idx).1 e
          exact ⟨m, x, y, e1, (hget2 m _).2 (Or.inl e2), e3⟩
        · have : idx = mg.moves.length := by simpa using e
          exact ⟨mg.edge_costs.length, a, b, by omega, (hget2 _ _).2 (Or.inr ⟨rfl, rfl⟩), hv⟩
      · rw [if_neg hv] at hin
        obtain ⟨m, x, y, e1, e2, e3⟩ := (h.base_iff v idx).1 hin
        exact ⟨m, x, y, e1, (hget2 m _).2 (Or.inl e2), e3⟩
    · rintro ⟨m, x, y, e1, e2, e3⟩
      rcases (hget2 m _).1 e2 with e | ⟨e, e4⟩
      · have := (h.base_iff v idx).2 ⟨m, x, y, e1, e, e3⟩
        split_ifs
        · exact List.mem_append_left _ this
        · exact this
      · have hxa : x = a := congrArg Prod.fst e4
        have hyb : y = b := congrArg Prod.snd e4
        rw [hxa, hyb] at e3
        rw [if_pos e3]
        refine List.mem_append_right _ ?_
        simp only [List.mem_singleton]
        omega
  · intro v
    rw [f4 v]
    split_ifs
    · refine List.Nodup.append (h.base_nodup v) (List.nodup_singleton _) ?_
      intro x hx hx2
      have hx3 : x = mg.moves.length := by simpa using hx2
      obtain ⟨m, x1, y1, e1, e2, _⟩ := (h.base_iff v x).1 hx
      have := hold m _ e2
      omega
    · exact h.base_nodup v
  · intro m m2 x y e1 e2
    rcases (hget2 m _).1 e1 with e | ⟨e, e3⟩
    · rcases (hget2 m2 _).1 e2 with e' | ⟨e', e3'⟩
      · exact h.uniq m m2 x y e e'
      · exact absurd ⟨m, by rw [← e3']; exact e⟩ hnew
    · rcases (hget2 m2 _).1 e2 with e' | ⟨e', _⟩
      · exact absurd ⟨m2, by rw [← e3]; exact e'⟩ hnew
      · omega
  · intro x y hxy
    constructor
    · rintro ⟨m, e⟩
      rcases (hget2 m _).1 e with e | ⟨_, e3⟩
      · obtain ⟨u, q, d, r⟩ := (h.present x y hxy).1 ⟨m, e⟩
        exact ⟨u, q, (hD u q).2 (Or.inl d), r⟩
      · have hxa : x = a := congrArg Prod.fst e3
        have hyb : y = b := congrArg Prod.snd e3
        rw [hxa, hyb]
        exact ⟨i, p, (hD i p).2 (Or.inr ⟨rfl, rfl⟩), hij⟩
    · rintro ⟨u, q, d, r⟩
      rcases (hD u q).1 d with d | ⟨d1, d2⟩
      · obtain ⟨m, e⟩ := (h.present x y hxy).2 ⟨u, q, d, r⟩
        exact ⟨m, (hget2 m _).2 (Or.inl e)⟩
      · refine ⟨mg.edge_costs.length, (hget2 _ _).2 (Or.inr ⟨rfl, ?_⟩)⟩
        rw [d1, d2] at r
        have hx : x = a ∧ y = b := by
          rcases r with ⟨r1, r2⟩ | ⟨r1, r2⟩ <;> rcases hij with ⟨s1, s2⟩ | ⟨s1, s2⟩ <;>
            constructor <;> omega
        rw [hx.1, hx.2]

/-- The pair of the position `(i, p)` that is processed is present already. -/
theorem PairsInv.skip {nb : Int → List Int} {mg : MoveGenerators} {D D2 : Int → Nat → Prop}
    (h : PairsInv nb mg D) {a b i : Int} {p : Nat} (hab : a < b)
    (hold : ∃ m, mg.moves[2 * m]? = some (a, b))
    (hD : ∀ x q, D2 x q ↔ (D x q ∨ (x = i ∧ q = p)))
    (hij : (i = a ∧ (nb i).getD p 0 = b) ∨ (i = b ∧ (nb i).getD p 0 = a)) :
    PairsInv nb mg D2 := by
  refine ⟨h.len, h.shape, h.base_iff, h.base_nodup, h.uniq, fun x y hxy => ?_⟩
  constructor
  · rintro ⟨m, e⟩
    obtain ⟨u, q, d, r⟩ := (h.present x y hxy).1 ⟨m, e⟩
    exact ⟨u, q, (hD u q).2 (Or.inl d), r⟩
  · rintro ⟨u, q, d, r⟩
    rcases (hD u q).1 d with d | ⟨d1, d2⟩
    · exact (h.present x y hxy).2 ⟨u, q, d, r⟩
    · rw [d1, d2] at r
      have hx : x = a ∧ y = b := by
        rcases r with ⟨r1, r2⟩ | ⟨r1, r2⟩ <;> rcases hij with ⟨s1, s2⟩ | ⟨s1, s2⟩ <;>
          constructor <;> omega
      rw [hx.1, hx.2]
      exact hold
theorem getD_inj_of_nodup {l : List Int} (h : l.Nodup) {p q : Nat} (hp : p < l.length)
    (hq : q < l.length) (e : l.getD p 0 = l.getD q 0) : p = q := by
  rw [List.getD_eq_getElem l 0 hp, List.getD_eq_getElem l 0 hq] at e
  exact (List.Nodup.getElem_inj_iff h).1 e

theorem getD_mem {l : List Int} {p : Nat} (hp : p < l.length) : l.getD p 0 ∈ l := by
  rw [List.getD_eq_getElem l 0 hp]
  exact List.getElem_mem hp

namespace MoveGenerators

theorem has_pair_iff {nb : Int → List Int} {mg : MoveGenerators} {D : Int → Nat → Prop}
    (h : PairsInv nb mg D) {j i : Int} (hji : j < i) :
    mg.has_pair j i = true ↔ ∃ m, mg.moves[2 * m]? = some (j, i) := by
  unfold has_pair
  rw [List.any_eq_true]
  constructor
  · rintro ⟨idx, hin, e⟩
    obtain ⟨m, a, b, e1, e2, e3⟩ := (h.base_iff j idx).1 hin
    have hm : m < mg.edge_costs.length := by
      have := (List.getElem?_eq_some.1 e2).1
      have := h.len
      omega
    obtain ⟨a2, b2, hab, e4, _⟩ := h.shape m hm
    have e5 : (a, b) = (a2, b2) := Option.some.inj (e2.symm.trans e4)
    have ha : a = a2 := congrArg Prod.fst e5
    have hb : b = b2 := congrArg Prod.snd e5
    have e6 : (mg.get idx).2 = i := by simpa using e
    have e7 : mg.get idx = (a, b) := by
      unfold get
      rw [e1, List.getD_eq_getElem?_getD, e2]
      rfl
    rw [e7] at e6
    have hbi : b = i := e6
    refine ⟨m, ?_⟩
    rw [e2]
    have : j = a := by
      rcases e3 with e3 | e3
      · exact e3
      · omega
    rw [this, hbi]
  · rintro ⟨m, e⟩
    refine ⟨2 * m, (h.base_iff j _).2 ⟨m, j, i, rfl, e, Or.inl rfl⟩, ?_⟩
    have : mg.get (2 * m) = (j, i) := by
      unfold get
      rw [List.getD_eq_getElem?_getD, e]
      rfl
    simp [this]

/-- One pass of the inner loop of the constructor keeps the invariant. -/
theorem pair_step_inv {I : Instance} {nb : Int → List Int} {K : Nat} (hnb : NbOK I nb K)
    (hsym : CostSym I) {mg : MoveGenerators} (hK : mg.max_num_neighbors = K) {i : Int}
    (hi0 : 0 ≤ i) (hiN : i < (I.vertices_num : Int)) {p : Nat} (hp1 : 1 ≤ p) (hpK : p ≤ K)
    (h : PairsInv nb mg (Done K i p)) :
    PairsInv nb (pair_step I nb mg i p) (Done K i (p + 1)) ∧
    (pair_step I nb mg i p).max_num_neighbors = K ∧
    (pair_step I nb mg i p).moves.length ≤ mg.moves.length + 2 := by
  have hD : ∀ x q, Done K i (p + 1) x q ↔ (Done K i p x q ∨ (x = i ∧ q = p)) := by
    intro x q
    unfold Done
    constructor
    · rintro ⟨a1, a2, a3, a4⟩
      by_cases e : x = i ∧ q = p
      · exact Or.inr e
      · left
        refine ⟨a1, a2, a3, ?_⟩
        rcases a4 with a4 | ⟨a4, a5⟩
        · exact Or.inl a4
        · right
          refine ⟨a4, ?_⟩
          have : q ≠ p := fun e2 => e ⟨a4, e2⟩
          omega
    · rintro (⟨a1, a2, a3, a4⟩ | ⟨a1, a2⟩)
      · refine ⟨a1, a2, a3, ?_⟩
        rcases a4 with a4 | ⟨a4, a5⟩
        · exact Or.inl a4
        · exact Or.inr ⟨a4, by omega⟩
      · rw [a1, a2]
        exact ⟨hi0, hp1, hpK, Or.inr ⟨rfl, Nat.lt_succ_self _⟩⟩
  have hlen := hnb.len i hi0 hiN
  have hjmem : (nb i).getD p 0 ∈ nb i := getD_mem (by omega)
  obtain ⟨hj0, hjN⟩ := hnb.range i hi0 hiN _ hjmem
  have hji : (nb i).getD p 0 ≠ i := by
    intro e
    have e0 := hnb.head i hi0 hiN
    have := getD_inj_of_nodup (hnb.nodup i hi0 hiN) (show p < (nb i).length by omega)
      (show 0 < (nb i).length by omega) (e.trans e0.symm)
    omega
  -- the pair cannot come from another position of the list of `i`
  have hself : ∀ q, Done K i p i q → (nb i).getD q 0 ≠ (nb i).getD p 0 := by
    rintro q ⟨_, _, b3, b4⟩ e
    have hq : q < p := by
      rcases b4 with b4 | ⟨_, b4⟩
      · omega
      · exact b4
    have := getD_inj_of_nodup (hnb.nodup i hi0 hiN) (show q < (nb i).length by omega)
      (show p < (nb i).length by omega) e
    omega
  have hlenj := hnb.len _ hj0 hjN
  have hK1 : 1 + mg.max_num_neighbors - 1 = K := by omega
  unfold pair_step
  simp only [hK1]
  by_cases c1 : i < (nb i).getD p 0
  · rw [if_pos c1]
    obtain ⟨f1, _, f3, _⟩ := insert_pair_fields mg (I.cost i ((nb i).getD p 0)) i
      ((nb i).getD p 0)
    refine ⟨h.insert_new _ c1 ?_ hD (Or.inl ⟨rfl, rfl⟩), f3.trans hK, by rw [f1]; simp⟩
    intro hex
    obtain ⟨x, q, d, r⟩ := (h.present _ _ c1).1 hex
    rcases r with ⟨r1, r2⟩ | ⟨r1, r2⟩
    · rw [r1] at d r2
      exact hself q d r2
    · rw [r1] at d
      obtain ⟨_, _, _, d4⟩ := d
      rcases d4 with d4 | ⟨d4, _⟩
      · omega
      · exact hji d4
  · rw [if_neg c1]
    have c2 : (nb i).getD p 0 < i := by omega
    -- the pair is present exactly when `i` is among the `K` neighbours of `j`
    have hpres : (∃ m, mg.moves[2 * m]? = some ((nb i).getD p 0, i)) ↔
        ∃ q, 1 ≤ q ∧ q ≤ K ∧ (nb ((nb i).getD p 0)).getD q 0 = i := by
      rw [h.present _ _ c2]
      constructor
      · rintro ⟨x, q, d, r⟩
        rcases r with ⟨r1, r2⟩ | ⟨r1, r2⟩
        · rw [r1] at d r2
          exact ⟨q, d.2.1, d.2.2.1, r2⟩
        · rw [r1] at d r2
          exact absurd r2 (hself q d)
      · rintro ⟨q, q1, q2, e⟩
        exact ⟨_, q, ⟨hj0, q1, q2, Or.inl c2⟩, Or.inl ⟨rfl, e⟩⟩
    have hcost : I.cost i ((nb i).getD p 0) = I.cost ((nb i).getD p 0) i := hsym.1 _ _
    obtain ⟨f1, _, f3, _⟩ := insert_pair_fields mg (I.cost i ((nb i).getD p 0))
      ((nb i).getD p 0) i
    by_cases c3 : I.cost i ((nb i).getD p 0) >
        I.cost ((nb i).getD p 0) ((nb ((nb i).getD p 0)).getD K 0)
    · rw [if_pos c3]
      refine ⟨h.insert_new _ c2 ?_ hD (Or.inr ⟨rfl, rfl⟩), f3.trans hK, by rw [f1]; simp⟩
      intro hex
      obtain ⟨q, q1, q2, e⟩ := hpres.1 hex
      have := hnb.sorted _ hj0 hjN q K q2 hlenj
      rw [e] at this
      omega
    · rw [if_neg c3]
      by_cases c4 : I.cost i ((nb i).getD p 0) =
          I.cost ((nb i).getD p 0) ((nb ((nb i).getD p 0)).getD K 0)
      · rw [if_pos c4]
        by_cases c5 : mg.has_pair ((nb i).getD p 0) i = true
        · rw [if_pos c5]
          exact ⟨h.skip c2 ((has_pair_iff h c2).1 c5) hD (Or.inr ⟨rfl, rfl⟩), hK, by omega⟩
        · rw [if_neg c5]
          exact ⟨h.insert_new _ c2 (fun hex => c5 ((has_pair_iff h c2).2 hex)) hD
            (Or.inr ⟨rfl, rfl⟩), f3.trans hK, by rw [f1]; simp⟩
      · rw [if_neg c4]
        refine ⟨h.skip c2 (hpres.2 ?_) hD (Or.inr ⟨rfl, rfl⟩), hK, by omega⟩
        have c6 : I.cost ((nb i).getD p 0) i <
            I.cost ((nb i).getD p 0) ((nb ((nb i).getD p 0)).getD K 0) := by omega
        have hKmem : (nb ((nb i).getD p 0)).getD K 0 ∈ nb ((nb i).getD p 0) := getD_mem hlenj
        have himem : i ∈ nb ((nb i).getD p 0) := by
          by_contra hni
          have := hnb.nearest _ hj0 hjN i hi0 hiN hni _ hKmem
          omega
        obtain ⟨q, hq, e⟩ := List.getElem_of_mem himem
        have e2 : (nb ((nb i).getD p 0)).getD q 0 = i := by
          rw [List.getD_eq_getElem _ 0 hq]; exact e
        refine ⟨q, ?_, ?_, e2⟩
        · by_contra hq0
          have hq00 : q = 0 := by omega
          rw [hq00, hnb.head _ hj0 hjN] at e2
          exact hji e2
        · by_contra hqK
          have := hnb.sorted _ hj0 hjN K q (by omega) hq
          rw [e2] at this
          omega

end MoveGenerators
theorem PairsInv.congr_done {nb : Int → List Int} {mg : MoveGenerators} {D D2 : Int → Nat → Prop}
    (h : PairsInv nb mg D) (hD : ∀ x q, D2 x q ↔ D x q) : PairsInv nb mg D2 :=
  ⟨h.len, h.shape, h.base_iff, h.base_nodup, h.uniq, fun a b hab => by
    rw [h.present a b hab]
    constructor
    · rintro ⟨x, q, d, r⟩
      exact ⟨x, q, (hD x q).2 d, r⟩
    · rintro ⟨x, q, d, r⟩
      exact ⟨x, q, (hD x q).1 d, r⟩⟩

namespace MoveGenerators

/-- The inner loop of the constructor, from position `s` on. -/
theorem pair_fold_inv {I : Instance} {nb : Int → List Int} {K : Nat} (hnb : NbOK I nb K)
    (hsym : CostSym I) {i : Int} (hi0 : 0 ≤ i) (hiN : i < (I.vertices_num : Int)) :
    ∀ (n s : Nat) (mg : MoveGenerators), 1 ≤ s → s + n ≤ K + 1 → mg.max_num_neighbors = K →
      PairsInv nb mg (Done K i s) →
      PairsInv nb ((List.range' s n).foldl (fun m p => pair_step I nb m i p) mg)
        (Done K i (s + n)) ∧
      ((List.range' s n).foldl (fun m p => pair_step I nb m i p) mg).max_num_neighbors = K ∧
      ((List.range' s n).foldl (fun m p => pair_step I nb m i p) mg).moves.length ≤
        mg.moves.length + 2 * n := by
  intro n
  induction n with
  | zero =>
    intro s mg _ _ hK h
    exact ⟨h, hK, by simp⟩
  | succ n ih =>
    intro s mg hs hsn hK h
    obtain ⟨a1, a2, a3⟩ := pair_step_inv hnb hsym hK hi0 hiN hs (by omega) h
    obtain ⟨b1, b2, b3⟩ := ih (s + 1) (pair_step I nb mg i s) (by omega) (by omega) a2 a1
    rw [List.range'_succ, List.foldl_cons]
    refine ⟨?_, b2, by omega⟩
    have e : s + (n + 1) = s + 1 + n := by omega
    rw [e]
    exact b1

/-- The inner loop of the constructor for vertex `i`. -/
theorem pair_loop_inv {I : Instance} {nb : Int → List Int} {K : Nat} (hnb : NbOK I nb K)
    (hsym : CostSym I) {i : Int} (hi0 : 0 ≤ i) (hiN : i < (I.vertices_num : Int))
    {mg : MoveGenerators} (hK : mg.max_num_neighbors = K) (h : PairsInv nb mg (Done K i 1)) :
    PairsInv nb (pair_loop I nb mg i) (Done K (i + 1) 1) ∧
    (pair_loop I nb mg i).max_num_neighbors = K ∧
    (pair_loop I nb mg i).moves.length ≤ mg.moves.length + 2 * K := by
  obtain ⟨a1, a2, a3⟩ := pair_fold_inv hnb hsym hi0 hiN K 1 mg (le_refl 1) (by omega) hK h
  unfold pair_loop
  rw [hK]
  refine ⟨a1.congr_done ?_, a2, a3⟩
  intro x q
  unfold Done
  constructor
  · rintro ⟨c1, c2, c3, c4⟩
    refine ⟨c1, c2, c3, ?_⟩
    rcases c4 with c4 | ⟨_, c4⟩
    · by_cases e : x = i
      · exact Or.inr ⟨e, by omega⟩
      · exact Or.inl (by omega)
    · omega
  · rintro ⟨c1, c2, c3, c4⟩
    refine ⟨c1, c2, c3, ?_⟩
    rcases c4 with c4 | ⟨c4, _⟩
    · exact Or.inl (by omega)
    · exact Or.inl (by omega)

/-- The first loop of the constructor, over the first `n` vertices. -/
theorem pair_loops_fold_inv {I : Instance} {nb : Int → List Int} {K : Nat}
    (hnb : NbOK I nb K) (hsym : CostSym I) {mg : MoveGenerators}
    (hK : mg.max_num_neighbors = K) (h : PairsInv nb mg (Done K 0 1)) :
    ∀ n, n ≤ I.vertices_num →
      PairsInv nb ((List.range n).foldl (fun (m : MoveGenerators) (i : Nat) => pair_loop I nb m (i : Int)) mg)
        (Done K (n : Int) 1) ∧
      ((List.range n).foldl (fun (m : MoveGenerators) (i : Nat) => pair_loop I nb m (i : Int)) mg).max_num_neighbors
        = K ∧
      ((List.range n).foldl (fun (m : MoveGenerators) (i : Nat) => pair_loop I nb m (i : Int)) mg).moves.length ≤
        mg.moves.length + 2 * (n * K) := by
  intro n
  induction n with
  | zero =>
    intro _
    exact ⟨h, hK, by simp⟩
  | succ n ih =>
    intro hn
    obtain ⟨a1, a2, a3⟩ := ih (by omega)
    rw [List.range_succ, List.foldl_append, List.foldl_cons, List.foldl_nil]
    obtain ⟨b1, b2, b3⟩ := pair_loop_inv hnb hsym (Int.ofNat_nonneg n)
      (show (n : Int) < (I.vertices_num : Int) by omega) a2 a1
    refine ⟨?_, b2, ?_⟩
    · have e : ((n + 1 : Nat) : Int) = (n : Int) + 1 := by push_cast; rfl
      rw [e]
      exact b1
    · have : (n + 1) * K = n * K + K := by ring
      omega

theorem init_inv (I : Instance) (nb : Int → List Int) (k K : Nat) :
    PairsInv nb (init I k) (Done K 0 1) :=
  ⟨rfl, fun m hm => absurd hm (by simp [init]),
    fun v idx => by simp [init],
    fun v => by simp [init],
    fun m m2 a b e => by simp [init] at e,
    fun a b hab => by
      constructor
      · rintro ⟨m, e⟩
        simp [init] at e
      · rintro ⟨x, q, ⟨d1, d2, d3, d4⟩, _⟩
        omega⟩

/-- The pairs that the first loop of the constructor leaves. -/
theorem pair_loops_inv {I : Instance} {nb : Int → List Int} {k : Nat}
    (hnb : NbOK I nb (min k (I.vertices_num - 1))) (hsym : CostSym I) :
    PairsInv nb (pair_loops I nb (init I k))
      (fun x q => 0 ≤ x ∧ x < (I.vertices_num : Int) ∧ 1 ≤ q ∧
        q ≤ min k (I.vertices_num - 1)) ∧
    (pair_loops I nb (init I k)).max_num_neighbors = min k (I.vertices_num - 1) ∧
    (pair_loops I nb (init I k)).moves.length ≤
      2 * (I.vertices_num * min k (I.vertices_num - 1)) := by
  obtain ⟨a1, a2, a3⟩ := pair_loops_fold_inv hnb hsym (show (init I k).max_num_neighbors = _
    from rfl) (init_inv I nb k _) I.vertices_num (le_refl _)
  refine ⟨a1.congr_done ?_, a2, by simpa [init] using a3⟩
  intro x q
  unfold Done
  constructor
  · rintro ⟨c1, c2, c3, c4⟩
    exact ⟨c1, c3, c4, Or.inl c2⟩
  · rintro ⟨c1, c2, c3, c4⟩
    refine ⟨c1, ?_, c2, c3⟩
    rcases c4 with c4 | ⟨_, c4⟩
    · exact c4
    · omega

end MoveGenerators
namespace MoveGenerators

/-- The second loop of the constructor, over the first `n` vertices: it replaces the base
indices of these vertices by their sorted permutation and changes nothing else. -/
theorem sort_fold_spec (mg : MoveGenerators) : ∀ n : Nat,
    ∃ f : Int → List Nat,
      (List.range n).foldl (fun (m : MoveGenerators) (i : Nat) =>
        m.set_base (i : Int) ((m.base_move_indices_involving (i : Int)).insertionSort
          (fun a b => m.get_edge_cost a ≤ m.get_edge_cost b))) mg
        = { mg with base_move_indices_involving := f } ∧
      ∀ v, f v = if 0 ≤ v ∧ v < (n : Int) then
          (mg.base_move_indices_involving v).insertionSort
            (fun a b => mg.get_edge_cost a ≤ mg.get_edge_cost b)
        else mg.base_move_indices_involving v := by
  intro n
  induction n with
  | zero =>
    refine ⟨mg.base_move_indices_involving, rfl, fun v => ?_⟩
    rw [if_neg]
    intro h
    have := h.2
    simp at this
    omega
  | succ n ih =>
    obtain ⟨f, e, hf⟩ := ih
    rw [List.range_succ, List.foldl_append, List.foldl_cons, List.foldl_nil, e]
    refine ⟨upd f (n : Int) ((f (n : Int)).insertionSort
      (fun a b => mg.get_edge_cost a ≤ mg.get_edge_cost b)), rfl, fun v => ?_⟩
    by_cases hv : v = (n : Int)
    · subst hv
      rw [upd_same, hf, if_neg (by omega), if_pos (by push_cast; omega)]
    · rw [upd_other _ _ _ _ hv, hf]
      by_cases c : 0 ≤ v ∧ v < (n : Int)
      · rw [if_pos c, if_pos ⟨c.1, by push_cast; omega⟩]
      · rw [if_neg c, if_neg]
        intro c2
        apply c
        refine ⟨c2.1, ?_⟩
        have := c2.2
        push_cast at this
        omega

/-- The second loop of the constructor. -/
theorem sort_loop_spec (I : Instance) (mg : MoveGenerators) :
    ∃ f : Int → List Nat,
      sort_loop I mg = { mg with base_move_indices_involving := f } ∧
      ∀ v, f v = if 0 ≤ v ∧ v < (I.vertices_num : Int) then
          (mg.base_move_indices_involving v).insertionSort
            (fun a b => mg.get_edge_cost a ≤ mg.get_edge_cost b)
        else mg.base_move_indices_involving v :=
  sort_fold_spec mg I.vertices_num

theorem sort_loop_perm (I : Instance) (mg : MoveGenerators) (v : Int) :
    ((sort_loop I mg).base_move_indices_involving v).Perm (mg.base_move_indices_involving v) := by
  obtain ⟨f, e, hf⟩ := sort_loop_spec I mg
  rw [e]
  show (f v).Perm _
  rw [hf]
  split
  · exact List.perm_insertionSort _ _
  · exact List.Perm.refl _

theorem sort_loop_moves (I : Instance) (mg : MoveGenerators) :
    (sort_loop I mg).moves = mg.moves ∧ (sort_loop I mg).edge_costs = mg.edge_costs ∧
    (sort_loop I mg).max_num_neighbors = mg.max_num_neighbors := by
  obtain ⟨f, e, hf⟩ := sort_loop_spec I mg
  rw [e]
  exact ⟨rfl, rfl, rfl⟩

/-- After the second loop the base indices of every vertex are in the order of increasing
edge cost. -/
theorem sort_loop_sorted (I : Instance) (mg : MoveGenerators) (v : Int) (hv0 : 0 ≤ v)
    (hvN : v < (I.vertices_num : Int)) :
    ((sort_loop I mg).base_move_indices_involving v).Sorted
      (fun a b => (sort_loop I mg).get_edge_cost a ≤ (sort_loop I mg).get_edge_cost b) := by
  obtain ⟨f, e, hf⟩ := sort_loop_spec I mg
  rw [e]
  show (f v).Sorted (fun a b => mg.get_edge_cost a ≤ mg.get_edge_cost b)
  rw [hf, if_pos ⟨hv0, hvN⟩]
  haveI : IsTotal Nat (fun a b => mg.get_edge_cost a ≤ mg.get_edge_cost b) :=
    ⟨fun a b => le_total _ _⟩
  haveI : IsTrans Nat (fun a b => mg.get_edge_cost a ≤ mg.get_edge_cost b) :=
    ⟨fun a b c h1 h2 => le_trans h1 h2⟩
  exact List.sorted_insertionSort _ _

end MoveGenerators

theorem PairsInv.sort {nb : Int → List Int} {mg : MoveGenerators} {D : Int → Nat → Prop}
    (h : PairsInv nb mg D) (I : Instance) : PairsInv nb (MoveGenerators.sort_loop I mg) D := by
  obtain ⟨e1, e2, _⟩ := MoveGenerators.sort_loop_moves I mg
  have hp := MoveGenerators.sort_loop_perm I mg
  refine ⟨by rw [e1, e2]; exact h.len, by rw [e1, e2]; exact h.shape, fun v idx => ?_,
    fun v => ((hp v).nodup_iff).2 (h.base_nodup v), by rw [e1]; exact h.uniq,
    by rw [e1]; exact h.present⟩
  rw [(hp v).mem_iff, e1]
  exact h.base_iff v idx
namespace MoveGenerators

/-- One pass of the inner loop adds at most one pair, whatever the neighbour lists are. -/
theorem pair_step_size (I : Instance) (nb : Int → List Int) (mg : MoveGenerators) (i : Int)
    (p : Nat) (n : Nat) (h : mg.moves.length = 2 * mg.edge_costs.length)
    (hn : mg.edge_costs.length ≤ n) :
    (pair_step I nb mg i p).moves.length = 2 * (pair_step I nb mg i p).edge_costs.length ∧
    (pair_step I nb mg i p).edge_costs.length ≤ n + 1 ∧
    (pair_step I nb mg i p).max_num_neighbors = mg.max_num_neighbors := by
  have key : ∀ c a b, (mg.insert_pair c a b).moves.length
        = 2 * (mg.insert_pair c a b).edge_costs.length ∧
      (mg.insert_pair c a b).edge_costs.length ≤ n + 1 ∧
      (mg.insert_pair c a b).max_num_neighbors = mg.max_num_neighbors := by
    intro c a b
    obtain ⟨f1, f2, f3, _⟩ := insert_pair_fields mg c a b
    rw [f1, f2, f3]
    simp only [List.length_append, List.length_cons, List.length_nil]
    exact ⟨by omega, by omega, trivial⟩
  have stay : mg.moves.length = 2 * mg.edge_costs.length ∧
      mg.edge_costs.length ≤ n + 1 ∧ mg.max_num_neighbors = mg.max_num_neighbors :=
    ⟨h, by omega, rfl⟩
  unfold pair_step
  simp only
  split_ifs
  · exact key _ _ _
  · exact key _ _ _
  · exact stay
  · exact key _ _ _
  · exact stay

theorem pair_fold_size (I : Instance) (nb : Int → List Int) (i : Int) :
    ∀ (l : List Nat) (mg : MoveGenerators) (n : Nat),
      mg.moves.length = 2 * mg.edge_costs.length → mg.edge_costs.length ≤ n →
      (l.foldl (fun m p => pair_step I nb m i p) mg).moves.length =
        2 * (l.foldl (fun m p => pair_step I nb m i p) mg).edge_costs.length ∧
      (l.foldl (fun m p => pair_step I nb m i p) mg).edge_costs.length ≤ n + l.length ∧
      (l.foldl (fun m p => pair_step I nb m i p) mg).max_num_neighbors
        = mg.max_num_neighbors := by
  intro l
  induction l with
  | nil =>
    intro mg n h hn
    exact ⟨h, hn, rfl⟩
  | cons p l ih =>
    intro mg n h hn
    obtain ⟨a1, a2, a3⟩ := pair_step_size I nb mg i p n h hn
    obtain ⟨b1, b2, b3⟩ := ih (pair_step I nb mg i p) (n + 1) a1 a2
    rw [List.foldl_cons]
    refine ⟨b1, ?_, b3.trans a3⟩
    rw [List.length_cons]
    omega

theorem pair_loop_size (I : Instance) (nb : Int → List Int) (mg : MoveGenerators) (i : Int)
    (n : Nat) (h : mg.moves.length = 2 * mg.edge_costs.length)
    (hn : mg.edge_costs.length ≤ n) :
    (pair_loop I nb mg i).moves.length = 2 * (pair_loop I nb mg i).edge_costs.length ∧
    (pair_loop I nb mg i).edge_costs.length ≤ n + mg.max_num_neighbors ∧
    (pair_loop I nb mg i).max_num_neighbors = mg.max_num_neighbors := by
  have := pair_fold_size I nb i (List.range' 1 mg.max_num_neighbors) mg n h hn
  rw [List.length_range'] at this
  exact this

theorem pair_loops_fold_size (I : Instance) (nb : Int → List Int) (mg : MoveGenerators)
    (h : mg.moves.length = 2 * mg.edge_costs.length) :
    ∀ n : Nat,
      ((List.range n).foldl (fun (m : MoveGenerators) (i : Nat) =>
        pair_loop I nb m (i : Int)) mg).moves.length =
        2 * ((List.range n).foldl (fun (m : MoveGenerators) (i : Nat) =>
          pair_loop I nb m (i : Int)) mg).edge_costs.length ∧
      ((List.range n).foldl (fun (m : MoveGenerators) (i : Nat) =>
        pair_loop I nb m (i : Int)) mg).edge_costs.length ≤
        mg.edge_costs.length + n * mg.max_num_neighbors ∧
      ((List.range n).foldl (fun (m : MoveGenerators) (i : Nat) =>
        pair_loop I nb m (i : Int)) mg).max_num_neighbors = mg.max_num_neighbors := by
  intro n
  induction n with
  | zero => exact ⟨h, by simp, rfl⟩
  | succ n ih =>
    obtain ⟨a1, a2, a3⟩ := ih
    rw [List.range_succ, List.foldl_append, List.foldl_cons, List.foldl_nil]
    obtain ⟨b1, b2, b3⟩ := pair_loop_size I nb _ (n : Int) _ a1 a2
    refine ⟨b1, ?_, b3.trans a3⟩
    rw [a3] at b2
    have : (n + 1) * mg.max_num_neighbors = n * mg.max_num_neighbors + mg.max_num_neighbors := by
      ring
    omega

/-- The constructor stores two moves and one edge cost for each pair, and at most
`N * K` pairs. -/
theorem create_size (I : Instance) (nb : Int → List Int) (k : Nat) :
    (create I nb k).size = 2 * (create I nb k).edge_costs.length ∧
    (create I nb k).edge_costs.length ≤ I.vertices_num * min k (I.vertices_num - 1) ∧
    (create I nb k).max_num_neighbors = min k (I.vertices_num - 1) := by
  obtain ⟨a1, a2, a3⟩ := pair_loops_fold_size I nb (init I k) rfl I.vertices_num
  obtain ⟨e1, e2, e3⟩ := sort_loop_moves I (pair_loops I nb (init I k))
  unfold create size
  rw [e1, e2, e3]
  refine ⟨a1, ?_, a3⟩
  have : (init I k).edge_costs.length = 0 := rfl
  rw [this, Nat.zero_add] at a2
  exact a2

end MoveGenerators
namespace MoveGenerators

theorem get_of_getElem? {mg : MoveGenerators} {idx : Nat} {x : Int × Int}
    (h : mg.moves[idx]? = some x) : mg.get idx = x := by
  unfold get
  rw [List.getD_eq_getElem?_getD, h]
  rfl

theorem getElem?_of_lt (mg : MoveGenerators) {idx : Nat} (h : idx < mg.moves.length) :
    mg.moves[idx]? = some (mg.get idx) := by
  unfold get
  rw [List.getD_eq_getElem _ _ h, List.getElem?_eq_getElem h]

end MoveGenerators

/-- The twin layout at the even index `2 * m`. -/
theorem PairsInv.twin {nb : Int → List Int} {mg : MoveGenerators} {D : Int → Nat → Prop}
    (h : PairsInv nb mg D) {m : Nat} (hm : 2 * m < mg.size) :
    (mg.get (2 * m)).1 < (mg.get (2 * m)).2 ∧
    mg.get (2 * m + 1) = ((mg.get (2 * m)).2, (mg.get (2 * m)).1) ∧
    2 * m + 1 < mg.size := by
  have hl := h.len
  unfold MoveGenerators.size at hm ⊢
  obtain ⟨a, b, hab, e1, e2⟩ := h.shape m (by omega)
  rw [MoveGenerators.get_of_getElem? e1, MoveGenerators.get_of_getElem? e2]
  exact ⟨hab, rfl, by omega⟩

/-- The pair of vertex `i` and of its neighbour at a processed position is present. -/
theorem PairsInv.has {I : Instance} {nb : Int → List Int} {K : Nat} (hnb : NbOK I nb K)
    {mg : MoveGenerators} {D : Int → Nat → Prop} (h : PairsInv nb mg D) {i : Int}
    (hi0 : 0 ≤ i) (hiN : i < (I.vertices_num : Int)) {p : Nat} (hp1 : 1 ≤ p) (hpK : p ≤ K)
    (hD : D i p) :
    (nb i).getD p 0 ≠ i ∧
    ∃ m, 2 * m ∈ mg.base_move_indices_involving i ∧
      (mg.get (2 * m) = (i, (nb i).getD p 0) ∨ mg.get (2 * m) = ((nb i).getD p 0, i)) := by
  have hlen := hnb.len i hi0 hiN
  have hji : (nb i).getD p 0 ≠ i := by
    intro e
    have e0 := hnb.head i hi0 hiN
    have := getD_inj_of_nodup (hnb.nodup i hi0 hiN) (show p < (nb i).length by omega)
      (show 0 < (nb i).length by omega) (e.trans e0.symm)
    omega
  refine ⟨hji, ?_⟩
  by_cases c : i < (nb i).getD p 0
  · obtain ⟨m, e⟩ := (h.present _ _ c).2 ⟨i, p, hD, Or.inl ⟨rfl, rfl⟩⟩
    exact ⟨m, (h.base_iff i _).2 ⟨m, _, _, rfl, e, Or.inl rfl⟩,
      Or.inl (MoveGenerators.get_of_getElem? e)⟩
  · have c2 : (nb i).getD p 0 < i := by omega
    obtain ⟨m, e⟩ := (h.present _ _ c2).2 ⟨i, p, hD, Or.inr ⟨rfl, rfl⟩⟩
    exact ⟨m, (h.base_iff i _).2 ⟨m, _, _, rfl, e, Or.inr rfl⟩,
      Or.inr (MoveGenerators.get_of_getElem? e)⟩

/-- A vertex whose `K` positions are processed has at least `K` base indices. -/
theorem PairsInv.base_length {I : Instance} {nb : Int → List Int} {K : Nat}
    (hnb : NbOK I nb K) {mg : MoveGenerators} {D : Int → Nat → Prop} (h : PairsInv nb mg D)
    {v : Int} (hv0 : 0 ≤ v) (hvN : v < (I.vertices_num : Int))
    (hD : ∀ q, 1 ≤ q → q ≤ K → D v q) : K ≤ (mg.base_move_indices_involving v).length := by
  have hlen := hnb.len v hv0 hvN
  have hnd : ((List.range' 1 K).map (fun q => (nb v).getD q 0)).Nodup := by
    refine List.Nodup.map_on ?_ (List.nodup_range' 1 K)
    intro x hx y hy e
    rw [List.mem_range'_1] at hx hy
    exact getD_inj_of_nodup (hnb.nodup v hv0 hvN) (by omega) (by omega) e
  have hsub : (List.range' 1 K).map (fun q => (nb v).getD q 0) ⊆
      (mg.base_move_indices_involving v).map (fun idx =>
        if (mg.get idx).1 = v then (mg.get idx).2 else (mg.get idx).1) := by
    intro j hj
    obtain ⟨q, hq, e⟩ := List.mem_map.1 hj
    rw [List.mem_range'_1] at hq
    obtain ⟨hne, m, hin, hm⟩ := h.has hnb hv0 hvN hq.1 (by omega) (hD q hq.1 (by omega))
    refine List.mem_map.2 ⟨2 * m, hin, ?_⟩
    rw [e] at hm hne
    rcases hm with hm | hm
    · rw [hm]
      simp
    · rw [hm]
      simp [hne]
  have := (List.subperm_of_subset hnd hsub).length_le
  simpa using this

/-- The invariant holds of the registry that the constructor returns, with all the `K`
positions of all the vertices processed. -/
theorem MoveGenerators.create_inv {I : Instance} {nb : Int → List Int} {k : Nat}
    (hnb : NbOK I nb (min k (I.vertices_num - 1))) (hsym : CostSym I) :
    PairsInv nb (MoveGenerators.create I nb k)
      (fun x q => 0 ≤ x ∧ x < (I.vertices_num : Int) ∧ 1 ≤ q ∧
        q ≤ min k (I.vertices_num - 1)) :=
  (MoveGenerators.pair_loops_inv hnb hsym).1.sort I
theorem threeInstance_sym : CostSym threeInstance :=
  ⟨fun i j => abs_sub_comm _ _, fun i => by simp [threeInstance]⟩

theorem three_cases {v : Int} (h0 : 0 ≤ v) (h3 : v < ((3 : Nat) : Int)) :
    v = 0 ∨ v = 1 ∨ v = 2 := by
  omega

theorem threeNb_ok (K : Nat) (hK : K ≤ 2) : NbOK threeInstance threeNb K where
  len := fun v h0 h3 => by
    rcases three_cases h0 h3 with e | e | e <;> subst e <;> simp [threeNb] <;> omega
  head := fun v h0 h3 => by
    rcases three_cases h0 h3 with e | e | e <;> subst e <;> simp [threeNb]
  nodup := fun v h0 h3 => by
    rcases three_cases h0 h3 with e | e | e <;> subst e <;> simp [threeNb]
  range := fun v h0 h3 u hu => by
    show 0 ≤ u ∧ u < ((3 : Nat) : Int)
    rcases three_cases h0 h3 with e | e | e <;> subst e <;> simp [threeNb] at hu <;>
      rcases hu with e | e | e <;> subst e <;> decide
  sorted := fun v h0 h3 p q hpq hq => by
    rcases three_cases h0 h3 with e | e | e <;> subst e <;>
      simp [threeNb] at hq <;> interval_cases q <;> interval_cases p <;>
      simp [threeNb, threeInstance]
  nearest := fun v h0 h3 u hu0 hu3 hu => by
    exfalso
    apply hu
    rcases three_cases h0 h3 with e | e | e <;> subst e <;>
      rcases three_cases hu0 hu3 with e | e | e <;> subst e <;> simp [threeNb]

/-! ## The active move generators -/

namespace SparseIntSet

theorem create_ok : SparseIntSet.create.OK := fun v => by simp [create]

theorem insert_set_ok {s : SparseIntSet} (h : s.OK) (x : Int) :
    (s.insert x).OK ∧ (s.insert x).flags x = true ∧
    ∀ u, s.flags u = true → (s.insert x).flags u = true := by
  unfold insert contains
  by_cases c : s.flags x = true
  · rw [if_pos c]
    exact ⟨h, c, fun u hu => hu⟩
  · rw [if_neg c]
    refine ⟨fun v => ?_, by simp [insert_without_checking_existance, upd], fun u hu => ?_⟩
    · simp only [insert_without_checking_existance, upd, List.mem_append, List.mem_singleton]
      by_cases e : v = x
      · simp [e]
      · simp [e, h v]
    · simp only [insert_without_checking_existance, upd]
      split
      · rfl
      · exact hu

theorem foldl_clear (l : List Int) : ∀ (f : Int → Bool) (u : Int),
    (l.foldl (fun f value => upd f value false) f) u = if u ∈ l then false else f u := by
  induction l with
  | nil => intro f u; simp
  | cons x l ih =>
    intro f u
    rw [List.foldl_cons, ih]
    by_cases c : u ∈ l
    · simp [c]
    · by_cases e : u = x
      · simp [c, e, upd]
      · simp [c, e, upd]

theorem clear_spec {s : SparseIntSet} (h : s.OK) :
    (∀ v, s.clear.flags v = false) ∧ s.clear.elements = [] ∧ s.clear.OK := by
  have h1 : ∀ v, s.clear.flags v = false := by
    intro v
    show (s.elements.foldl (fun f value => upd f value false) s.flags) v = false
    rw [foldl_clear]
    by_cases c : v ∈ s.elements
    · rw [if_pos c]
    · rw [if_neg c]
      have := (h v).not.2 c
      simpa using this
  refine ⟨h1, rfl, fun v => ?_⟩
  rw [h1 v]
  simp [clear]

end SparseIntSet

namespace MoveGenerators

theorem twin_even (m : Nat) : get_twin_move_generator_index (2 * m) = 2 * m + 1 := by
  unfold get_twin_move_generator_index
  apply Nat.eq_of_testBit_eq
  intro i
  rw [Nat.testBit_xor]
  cases i with
  | zero =>
    have : (2 * m + 1) % 2 = 1 := by omega
    simp [Nat.testBit_zero, this]
  | succ i =>
    have h1 : (1 : Nat).testBit (i + 1) = false := by
      rw [Nat.testBit_succ]
      simp
    rw [h1, Nat.testBit_succ, Nat.testBit_succ]
    have : (2 * m + 1) / 2 = m := by omega
    simp [this]

theorem Same.same_refl (mg : MoveGenerators) : mg.Same mg := ⟨rfl, rfl, rfl, rfl⟩

theorem Same.same_trans {a b c : MoveGenerators} (h1 : a.Same b) (h2 : b.Same c) : a.Same c :=
  ⟨h1.1.trans h2.1, h1.2.1.trans h2.2.1, h1.2.2.1.trans h2.2.2.1, h1.2.2.2.trans h2.2.2.2⟩

theorem Same.get {a b : MoveGenerators} (h : a.Same b) (idx : Nat) : a.get idx = b.get idx := by
  unfold MoveGenerators.get
  rw [h.1]

end MoveGenerators

theorem PairsInv.same {nb : Int → List Int} {mg mg2 : MoveGenerators} {D : Int → Nat → Prop}
    (h : PairsInv nb mg D) (hs : mg2.Same mg) : PairsInv nb mg2 D := by
  obtain ⟨e1, e2, e3, _⟩ := hs
  exact ⟨by rw [e1, e2]; exact h.len, by rw [e1, e2]; exact h.shape,
    by rw [e1, e3]; exact h.base_iff, by rw [e3]; exact h.base_nodup,
    by rw [e1]; exact h.uniq, by rw [e1]; exact h.present⟩

/-- A base index of `v` is even and in range, and `v` is one of the two distinct vertices of
its move. -/
theorem PairsInv.base_mem {nb : Int → List Int} {mg : MoveGenerators} {D : Int → Nat → Prop}
    (h : PairsInv nb mg D) {v : Int} {idx : Nat}
    (hin : idx ∈ mg.base_move_indices_involving v) :
    ∃ m, idx = 2 * m ∧ 2 * m < mg.size ∧ (mg.get idx).1 < (mg.get idx).2 ∧
      (v = (mg.get idx).1 ∨ v = (mg.get idx).2) ∧
      mg.get (2 * m + 1) = ((mg.get idx).2, (mg.get idx).1) := by
  obtain ⟨m, a, b, e1, e2, e3⟩ := (h.base_iff v idx).1 hin
  have hm : 2 * m < mg.size := (List.getElem?_eq_some.1 e2).1
  obtain ⟨t1, t2, _⟩ := h.twin hm
  rw [e1]
  refine ⟨m, rfl, hm, t1, ?_, t2⟩
  rw [MoveGenerators.get_of_getElem? e2]
  exact e3
namespace MoveGenerators

theorem toggle_step_fields (b : Bool) (m : MoveGenerators) (vertex : Int) (n : Nat) :
    (toggle_step b m vertex n).Same m ∧
    (toggle_step b m vertex n).active_move_indices_involving_1st
      = m.active_move_indices_involving_1st ∧
    (toggle_step b m vertex n).unique_endpoints = m.unique_endpoints ∧
    (toggle_step b m vertex n).current_num_neighbors = m.current_num_neighbors ∧
    (toggle_step b m vertex n).vertices_in_updated_moves =
      (m.vertices_in_updated_moves.insert
        (m.get ((m.base_move_indices_involving vertex).getD n 0)).1).insert
        (m.get ((m.base_move_indices_involving vertex).getD n 0)).2 ∧
    (toggle_step b m vertex n).move_active_in_1st =
      (if vertex = (m.get ((m.base_move_indices_involving vertex).getD n 0)).1 then
        upd m.move_active_in_1st ((m.base_move_indices_involving vertex).getD n 0 / 2) b
      else m.move_active_in_1st) ∧
    (toggle_step b m vertex n).move_active_in_2nd =
      (if vertex = (m.get ((m.base_move_indices_involving vertex).getD n 0)).1 then
        m.move_active_in_2nd
      else upd m.move_active_in_2nd ((m.base_move_indices_involving vertex).getD n 0 / 2) b) := by
  unfold toggle_step set_flag note_updated Same
  by_cases c : vertex = (m.get ((m.base_move_indices_involving vertex).getD n 0)).1
  · simp only [if_pos c]
    simp [get]
  · simp only [if_neg c]
    simp [get]

end MoveGenerators

/-- One pass of a loop that sets the flag of position `p` of `vertex` to `b`. -/
theorem Toggling.toggle {nb : Int → List Int} {D : Int → Nat → Prop} {m0 m : MoveGenerators}
    {A : Int → Nat → Prop} (hP : PairsInv nb m0 D) (h : Toggling m0 m A) (b : Bool)
    {vertex : Int} {p : Nat} (hp : p < (m.base_move_indices_involving vertex).length) :
    Toggling m0 (MoveGenerators.toggle_step b m vertex p)
      (fun v n => if v = vertex ∧ n = p then b = true else A v n) := by
  have hPm : PairsInv nb m D := hP.same h.same
  obtain ⟨f1, f2, f3, f4, f5, f6, f7⟩ := MoveGenerators.toggle_step_fields b m vertex p
  have hidx : (m.base_move_indices_involving vertex).getD p 0 ∈
      m.base_move_indices_involving vertex := by
    rw [List.getD_eq_getElem _ 0 hp]
    exact List.getElem_mem hp
  obtain ⟨j, ej, hj, hlt, hend, _⟩ := hPm.base_mem hidx
  generalize hdef : (m.base_move_indices_involving vertex).getD p 0 = idx at *
  have hj2 : idx / 2 = j := by omega
  obtain ⟨u1, u2, u3⟩ := SparseIntSet.insert_set_ok h.updated (m.get idx).1
  obtain ⟨w1, w2, w3⟩ := SparseIntSet.insert_set_ok u1 (m.get idx).2
  have hget : ∀ i, (MoveGenerators.toggle_step b m vertex p).get i = m.get i := f1.get
  refine ⟨f1.same_trans h.same, f2.trans h.lists, f3.trans h.endpoints, fun v n hn => ?_,
    by rw [f5]; exact w1, fun j2 hch => ?_⟩
  · rw [f1.2.2.1] at hn ⊢
    have hin2 : (m.base_move_indices_involving v).getD n 0 ∈ m.base_move_indices_involving v := by
      rw [List.getD_eq_getElem _ 0 hn]
      exact List.getElem_mem hn
    obtain ⟨j2, ej2, _, hlt2, hend2, _⟩ := hPm.base_mem hin2
    have hfl := h.flags v n hn
    generalize hdef2 : (m.base_move_indices_involving v).getD n 0 = idx2 at *
    unfold MoveGenerators.is_active_in at hfl ⊢
    rw [hget, f6, f7]
    by_cases hsame : idx2 = idx
    · rw [hsame] at hfl hend2 ⊢
      by_cases hv : v = vertex
      · have hnp : n = p := by
          subst hv
          have e0 : ((m.base_move_indices_involving v).getD n 0 : Nat) =
              (m.base_move_indices_involving v).getD p 0 :=
            hdef2.trans (hsame.trans hdef.symm)
          rw [List.getD_eq_getElem _ 0 hn, List.getD_eq_getElem _ 0 hp] at e0
          exact (List.Nodup.getElem_inj_iff (hPm.base_nodup v)).1 e0
        rw [if_pos (And.intro hv hnp), hv]
        by_cases c : vertex = (m.get idx).1
        · simp [c, upd]
        · simp [c, upd]
      · rw [if_neg (fun e : v = vertex ∧ n = p => hv e.1)]
        rw [← hfl]
        by_cases c : vertex = (m.get idx).1
        · have : v ≠ (m.get idx).1 := fun e => hv (e.trans c.symm)
          simp [c, this]
        · have : v = (m.get idx).1 := by
            rcases hend with e | e
            · exact absurd e c
            · rcases hend2 with e2 | e2
              · exact e2
              · exact absurd (e2.trans e.symm) hv
          simp [c, this]
    · have hne : idx2 / 2 ≠ idx / 2 := by omega
      have hcond : ¬ (v = vertex ∧ n = p) := by
        intro e
        apply hsame
        rw [← hdef2, e.1, e.2]
        exact hdef
      rw [if_neg hcond, ← hfl]
      by_cases c : vertex = (m.get idx).1
      · simp [c, upd, hne]
      · simp [c, upd, hne]
  · rw [hget, f5]
    by_cases e : j2 = j
    · rw [e, ← ej]
      exact ⟨w3 _ u2, w2⟩
    · have hne : j2 ≠ idx / 2 := by omega
      have hch2 : m.move_active_in_1st j2 ≠ m0.move_active_in_1st j2 ∨
          m.move_active_in_2nd j2 ≠ m0.move_active_in_2nd j2 := by
        rw [f6, f7] at hch
        by_cases c : vertex = (m.get idx).1
        · simpa [c, upd, hne] using hch
        · simpa [c, upd, hne] using hch
      obtain ⟨g1, g2⟩ := h.changed j2 hch2
      exact ⟨w3 _ (u3 _ g1), w3 _ (u3 _ g2)⟩

theorem Toggling.congr_flags {m0 m : MoveGenerators} {A A2 : Int → Nat → Prop}
    (h : Toggling m0 m A) (hA : ∀ v n, A2 v n ↔ A v n) : Toggling m0 m A2 :=
  ⟨h.same, h.lists, h.endpoints, fun v n hn => (h.flags v n hn).trans (hA v n).symm,
    h.updated, h.changed⟩

/-- The invariant depends on the moves, the base indices, the flags, the active lists and
the two sets only. -/
theorem Toggling.transfer {m0 m m2 : MoveGenerators} {A : Int → Nat → Prop}
    (h : Toggling m0 m A) (e1 : m2.Same m)
    (e2 : m2.active_move_indices_involving_1st = m.active_move_indices_involving_1st)
    (e3 : m2.unique_endpoints = m.unique_endpoints)
    (e4 : m2.move_active_in_1st = m.move_active_in_1st)
    (e5 : m2.move_active_in_2nd = m.move_active_in_2nd)
    (e6 : m2.vertices_in_updated_moves = m.vertices_in_updated_moves) : Toggling m0 m2 A := by
  have hget : ∀ i, m2.get i = m.get i := e1.get
  refine ⟨e1.same_trans h.same, e2.trans h.lists, e3.trans h.endpoints, fun v n hn => ?_,
    by rw [e6]; exact h.updated, fun j hj => ?_⟩
  · rw [e1.2.2.1] at hn ⊢
    have := h.flags v n hn
    unfold MoveGenerators.is_active_in at this ⊢
    rw [hget, e4, e5]
    exact this
  · rw [e4, e5] at hj
    rw [hget, e6]
    exact h.changed j hj

/-- A loop that sets the flags of the positions `lo, …, lo + cnt - 1` of `vertex` to `b`. -/
theorem Toggling.toggle_fold {nb : Int → List Int} {D : Int → Nat → Prop} {m0 : MoveGenerators}
    (hP : PairsInv nb m0 D) (b : Bool) (vertex : Int) :
    ∀ (cnt lo : Nat) (m : MoveGenerators) (A : Int → Nat → Prop), Toggling m0 m A →
      lo + cnt ≤ (m.base_move_indices_involving vertex).length →
      Toggling m0
        ((List.range' lo cnt).foldl (fun m n => MoveGenerators.toggle_step b m vertex n) m)
        (fun v n => if v = vertex ∧ lo ≤ n ∧ n < lo + cnt then b = true else A v n) ∧
      ((List.range' lo cnt).foldl (fun m n => MoveGenerators.toggle_step b m vertex n)
        m).current_num_neighbors = m.current_num_neighbors := by
  intro cnt
  induction cnt with
  | zero =>
    intro lo m A h _
    refine ⟨h.congr_flags (fun v n => ?_), rfl⟩
    rw [if_neg]
    omega
  | succ cnt ih =>
    intro lo m A h hlen
    have hs := h.toggle hP b (show lo < (m.base_move_indices_involving vertex).length by omega)
    obtain ⟨f1, _, _, f4, _⟩ := MoveGenerators.toggle_step_fields b m vertex lo
    obtain ⟨a1, a2⟩ := ih (lo + 1) _ _ hs (by rw [f1.2.2.1]; omega)
    rw [List.range'_succ, List.foldl_cons]
    refine ⟨a1.congr_flags (fun v n => ?_), a2.trans f4⟩
    by_cases c1 : v = vertex ∧ lo ≤ n ∧ n < lo + (cnt + 1)
    · rw [if_pos c1]
      by_cases c2 : v = vertex ∧ lo + 1 ≤ n ∧ n < lo + 1 + cnt
      · rw [if_pos c2]
      · rw [if_neg c2, if_pos ⟨c1.1, by omega⟩]
    · rw [if_neg c1, if_neg (fun c2 => c1 ⟨c2.1, by omega, by omega⟩),
        if_neg (fun c2 => c1 ⟨c2.1, by omega, by omega⟩)]

theorem foldl_upd_target (num2 : Int → Nat) : ∀ (vertices : List Int) (c : Int → Nat) (u : Int),
    (vertices.foldl (fun c v => upd c v (num2 v)) c) u =
      if u ∈ vertices then num2 u else c u := by
  intro vertices
  induction vertices with
  | nil => intro c u; simp
  | cons x l ih =>
    intro c u
    rw [List.foldl_cons, ih]
    by_cases h1 : u ∈ l
    · simp [h1]
    · by_cases h2 : u = x
      · simp [h1, h2, upd]
      · simp [h1, h2, upd]

namespace MoveGenerators

theorem update_vertex_same (m : MoveGenerators) (t : Nat) (vertex : Int)
    (h : t = m.current_num_neighbors vertex) : m.update_vertex t vertex = m := by
  unfold update_vertex
  rw [if_pos h]

theorem update_vertex_less (m : MoveGenerators) (t : Nat) (vertex : Int)
    (h : t < m.current_num_neighbors vertex) :
    m.update_vertex t vertex =
      ((List.range' t (m.current_num_neighbors vertex - t)).foldl
        (fun m n => toggle_step false m vertex n)
        (m.push_getting_updated vertex)).set_current vertex t := by
  unfold update_vertex
  rw [if_neg (by omega)]
  simp only [if_pos h]
  rfl

theorem update_vertex_more (m : MoveGenerators) (t : Nat) (vertex : Int)
    (h : m.current_num_neighbors vertex < t) :
    m.update_vertex t vertex =
      ((List.range' (m.current_num_neighbors vertex) (t - m.current_num_neighbors vertex)).foldl
        (fun m n => toggle_step true m vertex n)
        (m.push_getting_updated vertex)).set_current vertex t := by
  unfold update_vertex
  rw [if_neg (by omega)]
  simp only [if_neg (show ¬ t < m.current_num_neighbors vertex by omega)]
  rfl

end MoveGenerators

theorem Toggling.set_current {m0 m : MoveGenerators} {A : Int → Nat → Prop}
    (h : Toggling m0 m A) (vertex : Int) (t : Nat) : Toggling m0 (m.set_current vertex t) A :=
  h.transfer ⟨rfl, rfl, rfl, rfl⟩ rfl rfl rfl rfl rfl

/-- The body of the first loop of `set_active_percentage` for `vertex` leaves the first `t`
positions of `vertex` active in its role. -/
theorem Toggling.update_vertex {nb : Int → List Int} {D : Int → Nat → Prop}
    {m0 m : MoveGenerators} (hP : PairsInv nb m0 D) {c : Int → Nat}
    (h : Toggling m0 m (fun v n => n < c v)) (hc : ∀ v, m.current_num_neighbors v = c v)
    (hb : ∀ v, c v ≤ (m.base_move_indices_involving v).length) (t : Nat) (vertex : Int)
    (ht : t ≤ (m.base_move_indices_involving vertex).length) :
    Toggling m0 (m.update_vertex t vertex) (fun v n => n < upd c vertex t v) ∧
    (∀ v, (m.update_vertex t vertex).current_num_neighbors v = upd c vertex t v) ∧
    (∀ v, upd c vertex t v ≤ ((m.update_vertex t vertex).base_move_indices_involving v).length) := by
  by_cases c1 : t = m.current_num_neighbors vertex
  · rw [MoveGenerators.update_vertex_same m t vertex c1]
    have e : ∀ v, upd c vertex t v = c v := by
      intro v
      unfold upd
      split
      · next hv => rw [c1, hc, hv]
      · rfl
    exact ⟨h.congr_flags (fun v n => by rw [e]), fun v => by rw [e]; exact hc v,
      fun v => by rw [e]; exact hb v⟩
  · have h1 : Toggling m0 (m.push_getting_updated vertex) (fun v n => n < c v) :=
      h.transfer ⟨rfl, rfl, rfl, rfl⟩ rfl rfl rfl rfl rfl
    have hcv := hc vertex
    have hbv := hb vertex
    have hbound : ∀ v, upd c vertex t v ≤ (m.base_move_indices_involving v).length := by
      intro v
      unfold upd
      split
      · next hv => rw [hv]; exact ht
      · exact hb v
    have hcur : ∀ v, upd m.current_num_neighbors vertex t v = upd c vertex t v := by
      intro v
      unfold upd
      split
      · rfl
      · exact hc v
    by_cases c2 : t < m.current_num_neighbors vertex
    · rw [MoveGenerators.update_vertex_less m t vertex c2]
      obtain ⟨a1, a2⟩ := Toggling.toggle_fold hP false vertex
        (m.current_num_neighbors vertex - t) t _ _ h1
        (show t + (m.current_num_neighbors vertex - t) ≤
          (m.base_move_indices_involving vertex).length by omega)
      have a3 := a1.same
      refine ⟨?_, fun v => ?_, fun v => ?_⟩
      · refine (a1.set_current vertex t).congr_flags (fun v n => ?_)
        unfold upd
        by_cases hv : v = vertex
        · subst hv
          simp only [true_and, if_true]
          by_cases c3 : t ≤ n ∧ n < t + (m.current_num_neighbors v - t)
          · rw [if_pos c3]
            simp
            omega
          · rw [if_neg c3]
            omega
        · simp [hv]
      · show upd _ vertex t v = _
        rw [a2]
        exact hcur v
      · show _ ≤ (List.length (MoveGenerators.base_move_indices_involving _ v))
        have : ∀ x : MoveGenerators, (x.set_current vertex t).base_move_indices_involving
            = x.base_move_indices_involving := fun x => rfl
        rw [this, a3.2.2.1, h.same.2.2.1.symm]
        exact hbound v
    · rw [MoveGenerators.update_vertex_more m t vertex (by omega)]
      obtain ⟨a1, a2⟩ := Toggling.toggle_fold hP true vertex
        (t - m.current_num_neighbors vertex) (m.current_num_neighbors vertex) _ _ h1
        (show m.current_num_neighbors vertex + (t - m.current_num_neighbors vertex) ≤
          (m.base_move_indices_involving vertex).length by omega)
      have a3 := a1.same
      refine ⟨?_, fun v => ?_, fun v => ?_⟩
      · refine (a1.set_current vertex t).congr_flags (fun v n => ?_)
        unfold upd
        by_cases hv : v = vertex
        · subst hv
          simp only [true_and, if_true]
          by_cases c3 : m.current_num_neighbors v ≤ n ∧
              n < m.current_num_neighbors v + (t - m.current_num_neighbors v)
          · rw [if_pos c3]
            simp
            omega
          · rw [if_neg c3]
            omega
        · simp [hv]
      · show upd _ vertex t v = _
        rw [a2]
        exact hcur v
      · show _ ≤ (List.length (MoveGenerators.base_move_indices_involving _ v))
        have : ∀ x : MoveGenerators, (x.set_current vertex t).base_move_indices_involving
            = x.base_move_indices_involving := fun x => rfl
        rw [this, a3.2.2.1, h.same.2.2.1.symm]
        exact hbound v

/-- The first loop of `set_active_percentage`. -/
theorem Toggling.update_fold {nb : Int → List Int} {D : Int → Nat → Prop}
    {m0 : MoveGenerators} (hP : PairsInv nb m0 D) (num2 : Int → Nat) :
    ∀ (vertices : List Int) (m : MoveGenerators) (c : Int → Nat),
      Toggling m0 m (fun v n => n < c v) → (∀ v, m.current_num_neighbors v = c v) →
      (∀ v, c v ≤ (m.base_move_indices_involving v).length) →
      (∀ v ∈ vertices, num2 v ≤ (m0.base_move_indices_involving v).length) →
      Toggling m0 (vertices.foldl (fun m vertex => m.update_vertex (num2 vertex) vertex) m)
        (fun v n => n < vertices.foldl (fun c v => upd c v (num2 v)) c v) ∧
      (∀ v, (vertices.foldl (fun m vertex => m.update_vertex (num2 vertex) vertex)
        m).current_num_neighbors v = vertices.foldl (fun c v => upd c v (num2 v)) c v) ∧
      (∀ v, vertices.foldl (fun c v => upd c v (num2 v)) c v ≤
        ((vertices.foldl (fun m vertex => m.update_vertex (num2 vertex) vertex)
          m).base_move_indices_involving v).length) := by
  intro vertices
  induction vertices with
  | nil =>
    intro m c h hc hb _
    exact ⟨h, hc, hb⟩
  | cons x l ih =>
    intro m c h hc hb ht
    have hx : num2 x ≤ (m.base_move_indices_involving x).length := by
      rw [h.same.2.2.1]
      exact ht x (List.mem_cons_self x l)
    obtain ⟨a1, a2, a3⟩ := h.update_vertex hP hc hb (num2 x) x hx
    rw [List.foldl_cons, List.foldl_cons]
    exact ih _ _ a1 a2 a3 (fun v hv => ht v (List.mem_cons_of_mem x hv))

/-- The state in which the first loop of `set_active_percentage` starts. -/
theorem ActiveOK.start {mg : MoveGenerators} {num : Int → Nat} (h : ActiveOK mg num) :
    Toggling mg.clear_updated mg.clear_updated (fun v n => n < num v) :=
  ⟨MoveGenerators.Same.same_refl _, rfl, rfl, fun v n hn => h.flags v n hn,
    (SparseIntSet.clear_spec h.updated).2.2, fun j hj => by
      rcases hj with hj | hj
      · exact absurd rfl hj
      · exact absurd rfl hj⟩

/-- The move of a base index of `v`, oriented to begin with `v`. -/
theorem PairsInv.orient_spec {nb : Int → List Int} {mg : MoveGenerators} {D : Int → Nat → Prop}
    (h : PairsInv nb mg D) {v : Int} {b : Nat} (hin : b ∈ mg.base_move_indices_involving v) :
    mg.orient v b < mg.size ∧ mg.orient v b / 2 = b / 2 ∧ (mg.get (mg.orient v b)).1 = v ∧
    (mg.get (mg.orient v b)).2 ≠ v ∧
    (mg.get b = (v, (mg.get (mg.orient v b)).2) ∨
      mg.get b = ((mg.get (mg.orient v b)).2, v)) := by
  obtain ⟨j, ej, hj, hlt, hend, htw⟩ := h.base_mem hin
  obtain ⟨_, _, hj1⟩ := h.twin hj
  unfold MoveGenerators.orient
  by_cases c : v = (mg.get b).1
  · rw [if_pos c]
    refine ⟨by rw [ej]; exact hj, rfl, c.symm, ?_, Or.inl ?_⟩
    · rw [c]; exact ne_of_gt hlt
    · rw [c]
  · have hv : v = (mg.get b).2 := by
      rcases hend with e | e
      · exact absurd e c
      · exact e
    rw [if_neg c, ej, MoveGenerators.twin_even, htw, ← ej]
    refine ⟨by omega, by omega, hv.symm, ?_, Or.inr ?_⟩
    · show (mg.get b).1 ≠ v
      rw [hv]; exact ne_of_lt hlt
    · show mg.get b = ((mg.get b).1, v)
      rw [hv]

/-- Two base indices of `v` with the same other endpoint are equal. -/
theorem PairsInv.orient_inj {nb : Int → List Int} {mg : MoveGenerators} {D : Int → Nat → Prop}
    (h : PairsInv nb mg D) {v : Int} {b1 b2 : Nat}
    (h1 : b1 ∈ mg.base_move_indices_involving v) (h2 : b2 ∈ mg.base_move_indices_involving v)
    (e : (mg.get (mg.orient v b1)).2 = (mg.get (mg.orient v b2)).2) : b1 = b2 := by
  obtain ⟨j1, ej1, hj1, hlt1, _, _⟩ := h.base_mem h1
  obtain ⟨j2, ej2, hj2, hlt2, _, _⟩ := h.base_mem h2
  obtain ⟨_, _, _, _, o1⟩ := h.orient_spec h1
  obtain ⟨_, _, _, _, o2⟩ := h.orient_spec h2
  rw [e] at o1
  have hg : mg.get b1 = mg.get b2 := by
    rcases o1 with o1 | o1 <;> rcases o2 with o2 | o2
    · rw [o1, o2]
    · rw [o1] at hlt1
      rw [o2] at hlt2
      exact absurd hlt1 (not_lt.2 (le_of_lt hlt2))
    · rw [o1] at hlt1
      rw [o2] at hlt2
      exact absurd hlt1 (not_lt.2 (le_of_lt hlt2))
    · rw [o1, o2]
  have g1 := mg.getElem?_of_lt hj1
  have g2 := mg.getElem?_of_lt hj2
  rw [← ej1] at g1
  rw [← ej2, ← hg] at g2
  rcases hx : mg.get b1 with ⟨a, c⟩
  rw [hx, ej1] at g1
  rw [hx, ej2] at g2
  rw [ej1, ej2, h.uniq j1 j2 a c g1 g2]

namespace MoveGenerators

theorem Kept.kept_refl (m : MoveGenerators) : m.Kept m := ⟨Same.same_refl m, rfl, rfl, rfl, rfl⟩

theorem Kept.kept_trans {a b c : MoveGenerators} (h1 : a.Kept b) (h2 : b.Kept c) : a.Kept c :=
  ⟨h1.1.same_trans h2.1, h1.2.1.trans h2.2.1, h1.2.2.1.trans h2.2.2.1,
    h1.2.2.2.1.trans h2.2.2.2.1, h1.2.2.2.2.trans h2.2.2.2.2⟩

theorem Kept.any {r m : MoveGenerators} (h : r.Kept m) (idx : Nat) :
    r.is_active_in_any idx = m.is_active_in_any idx := by
  unfold is_active_in_any
  rw [h.2.1, h.2.2.1]

theorem Kept.active_in {r m : MoveGenerators} (h : r.Kept m) (idx : Nat) (v : Int) :
    r.is_active_in idx v = m.is_active_in idx v := by
  unfold is_active_in
  rw [h.2.1, h.2.2.1, h.1.get]

theorem Kept.orient_eq {r m : MoveGenerators} (h : r.Kept m) (v : Int) (b : Nat) :
    r.orient v b = m.orient v b := by
  unfold MoveGenerators.orient
  rw [h.1.get]

theorem Kept.oriented {r m : MoveGenerators} (h : r.Kept m) (v : Int) :
    r.oriented v = m.oriented v := by
  unfold MoveGenerators.oriented
  rw [h.1.2.2.1]
  have e1 : (fun b => r.is_active_in_any b) = fun b => m.is_active_in_any b :=
    funext (fun b => h.any b)
  have e2 : (fun b => r.orient v b) = fun b => m.orient v b := funext (fun b => h.orient_eq v b)
  rw [e1, e2]

end MoveGenerators

namespace MoveGenerators

/-- The loop over the base indices of `vertex` in the second loop of
`set_active_percentage`: it appends the oriented indices of the active moves. -/
theorem rebuild_fold {nb : Int → List Int} {D : Int → Nat → Prop} {mref : MoveGenerators}
    (hP : PairsInv nb mref D) (vertex : Int) :
    ∀ (l : List Nat) (m : MoveGenerators), m.Kept mref →
      m.active_move_indices_involving_1st = mref.active_move_indices_involving_1st →
      m.unique_endpoints.OK → (∀ b ∈ l, b ∈ mref.base_move_indices_involving vertex) →
      l.Nodup →
      (∀ b ∈ l, (mref.get (mref.orient vertex b)).2 ∉ m.unique_endpoints.elements) →
      (l.foldl (fun m b => m.rebuild_step vertex b) m).Kept mref ∧
      (l.foldl (fun m b => m.rebuild_step vertex b) m).active_move_indices_involving_1st
        = mref.active_move_indices_involving_1st ∧
      (l.foldl (fun m b => m.rebuild_step vertex b) m).unique_endpoints.OK ∧
      (l.foldl (fun m b => m.rebuild_step vertex b) m).unique_move_generators =
        m.unique_move_generators ++
          (l.filter (fun b => mref.is_active_in_any b)).map (fun b => mref.orient vertex b) := by
  intro l
  induction l with
  | nil =>
    intro m hk ha hu _ _ _
    exact ⟨hk, ha, hu, by simp⟩
  | cons b l ih =>
    intro m hk ha hu hin hnd hnot
    rw [List.foldl_cons]
    have hnd2 := (List.nodup_cons.1 hnd).2
    have hbl := (List.nodup_cons.1 hnd).1
    have hin2 : ∀ b2 ∈ l, b2 ∈ mref.base_move_indices_involving vertex :=
      fun b2 h2 => hin b2 (List.mem_cons_of_mem b h2)
    by_cases hact : mref.is_active_in_any b = true
    · have hj : (mref.get (mref.orient vertex b)).2 ∉ m.unique_endpoints.elements :=
        hnot b (List.mem_cons_self b l)
      have hfl : m.unique_endpoints.flags (mref.get (mref.orient vertex b)).2 = false := by
        have := (hu (mref.get (mref.orient vertex b)).2).not.2 hj
        simpa using this
      have hstep : m.rebuild_step vertex b =
          m.push_unique (mref.get (mref.orient vertex b)).2 (mref.orient vertex b) := by
        unfold rebuild_step
        have e1 : m.is_active_in_any b = true := (hk.any b).trans hact
        have e2 : (if vertex = (mref.get b).1 then b else get_twin_move_generator_index b)
            = mref.orient vertex b := rfl
        simp [e1, e2, hk.1.get, SparseIntSet.contains, hfl]
      rw [hstep]
      have hk2 : (m.push_unique (mref.get (mref.orient vertex b)).2
          (mref.orient vertex b)).Kept mref := hk
      have hu2 : (m.push_unique (mref.get (mref.orient vertex b)).2
          (mref.orient vertex b)).unique_endpoints.OK := by
        intro v
        show upd m.unique_endpoints.flags _ true v = true ↔ v ∈ m.unique_endpoints.elements ++ [_]
        rw [List.mem_append, List.mem_singleton]
        unfold upd
        by_cases e : v = (mref.get (mref.orient vertex b)).2
        · simp [e]
        · simp [e, hu v]
      obtain ⟨a1, a2, a3, a4⟩ := ih _ hk2 ha hu2 hin2 hnd2 (by
        intro b2 h2 hmem
        have hmem2 : (mref.get (mref.orient vertex b2)).2 ∈
            m.unique_endpoints.elements ++ [(mref.get (mref.orient vertex b)).2] := hmem
        rw [List.mem_append, List.mem_singleton] at hmem2
        rcases hmem2 with hm | hm
        · exact hnot b2 (List.mem_cons_of_mem b h2) hm
        · have := hP.orient_inj (hin2 b2 h2) (hin b (List.mem_cons_self b l)) hm
          rw [this] at h2
          exact hbl h2)
      refine ⟨a1, a2, a3, ?_⟩
      rw [a4, List.filter_cons_of_pos (by simpa using hact), List.map_cons]
      show (m.unique_move_generators ++ [_]) ++ _ = _
      rw [List.append_assoc]
      rfl
    · have hstep : m.rebuild_step vertex b = m := by
        unfold rebuild_step
        have e1 : m.is_active_in_any b = false := by
          rw [hk.any b]
          simpa using hact
        simp [e1]
      rw [hstep]
      obtain ⟨a1, a2, a3, a4⟩ := ih m hk ha hu hin2 hnd2
        (fun b2 h2 => hnot b2 (List.mem_cons_of_mem b h2))
      refine ⟨a1, a2, a3, ?_⟩
      rw [a4, List.filter_cons_of_neg (by simpa using hact)]

/-- The body of the second loop of `set_active_percentage` stores the oriented active
moves of `vertex` as its active list. -/
theorem rebuild_vertex_spec {nb : Int → List Int} {D : Int → Nat → Prop} {m : MoveGenerators}
    (hP : PairsInv nb m D) (hu : m.unique_endpoints.OK) (vertex : Int) :
    (m.rebuild_vertex vertex).Kept m ∧ (m.rebuild_vertex vertex).unique_endpoints.OK ∧
    (m.rebuild_vertex vertex).active_move_indices_involving_1st =
      upd m.active_move_indices_involving_1st vertex (m.oriented vertex) := by
  obtain ⟨c1, c2, c3⟩ := SparseIntSet.clear_spec hu
  obtain ⟨a1, a2, a3, a4⟩ := rebuild_fold hP vertex (m.base_move_indices_involving vertex)
    m.clear_unique (Kept.kept_refl m) rfl c3 (fun b hb => hb) (hP.base_nodup vertex)
    (fun b _ hmem => by
      have : (m.get (m.orient vertex b)).2 ∈ m.unique_endpoints.clear.elements := hmem
      rw [c2] at this
      simp at this)
  unfold rebuild_vertex
  refine ⟨a1, a3, ?_⟩
  show upd _ vertex _ = _
  have e : m.clear_unique.base_move_indices_involving = m.base_move_indices_involving := rfl
  simp only [e]
  rw [a2, a4]
  rfl

end MoveGenerators

namespace MoveGenerators

/-- The second loop of `set_active_percentage`. -/
theorem rebuild_all {nb : Int → List Int} {D : Int → Nat → Prop} {mref : MoveGenerators}
    (hP : PairsInv nb mref D) :
    ∀ (els : List Int) (m : MoveGenerators), m.Kept mref → m.unique_endpoints.OK →
      (els.foldl (fun m vertex => m.rebuild_vertex vertex) m).Kept mref ∧
      (els.foldl (fun m vertex => m.rebuild_vertex vertex) m).unique_endpoints.OK ∧
      ∀ v, (els.foldl (fun m vertex => m.rebuild_vertex vertex)
        m).active_move_indices_involving_1st v =
          if v ∈ els then mref.oriented v else m.active_move_indices_involving_1st v := by
  intro els
  induction els with
  | nil =>
    intro m hk hu
    exact ⟨hk, hu, fun v => by simp⟩
  | cons x l ih =>
    intro m hk hu
    obtain ⟨a1, a2, a3⟩ := rebuild_vertex_spec (hP.same hk.1) hu x
    obtain ⟨b1, b2, b3⟩ := ih _ (a1.kept_trans hk) a2
    rw [List.foldl_cons]
    refine ⟨b1, b2, fun v => ?_⟩
    rw [b3, a3, hk.oriented]
    by_cases h1 : v ∈ l
    · simp [h1]
    · by_cases h2 : v = x
      · simp [h1, h2, upd]
      · simp [h1, h2, upd]

end MoveGenerators

/-- A vertex that is not in `vertices_in_updated_moves` after the first loop has the
oriented active moves it had before. -/
theorem Toggling.oriented_eq {nb : Int → List Int} {D : Int → Nat → Prop}
    {m0 m : MoveGenerators} {A : Int → Nat → Prop} (hP : PairsInv nb m0 D)
    (h : Toggling m0 m A) {v : Int} (hv : v ∉ m.vertices_in_updated_moves.elements) :
    m.oriented v = m0.oriented v := by
  have hPm : PairsInv nb m D := hP.same h.same
  unfold MoveGenerators.oriented
  have e2 : (fun b => m.orient v b) = fun b => m0.orient v b := by
    funext b
    unfold MoveGenerators.orient
    rw [h.same.get]
  rw [e2, ← h.same.2.2.1]
  congr 1
  apply List.filter_congr
  intro b hb
  obtain ⟨j, ej, _, _, hend, _⟩ := hPm.base_mem hb
  have hj : b / 2 = j := by omega
  unfold MoveGenerators.is_active_in_any
  rw [hj]
  by_cases hch : m.move_active_in_1st j ≠ m0.move_active_in_1st j ∨
      m.move_active_in_2nd j ≠ m0.move_active_in_2nd j
  · exfalso
    obtain ⟨g1, g2⟩ := h.changed j hch
    rw [← ej] at g1 g2
    rcases hend with e | e
    · rw [← e] at g1
      exact hv ((h.updated v).1 g1)
    · rw [← e] at g2
      exact hv ((h.updated v).1 g2)
  · have : m.move_active_in_1st j = m0.move_active_in_1st j ∧
        m.move_active_in_2nd j = m0.move_active_in_2nd j := by
      by_contra hne
      apply hch
      by_cases c : m.move_active_in_1st j = m0.move_active_in_1st j
      · exact Or.inr (fun e => hne ⟨c, e⟩)
      · exact Or.inl c
    rw [this.1, this.2]

/-- A call of `set_active_percentage` keeps the invariant of the activity data, for the
numbers of neighbours it is given. -/
theorem ActiveOK.set_active_percentage {nb : Int → List Int} {D : Int → Nat → Prop}
    {mg : MoveGenerators} {num : Int → Nat} (hP : PairsInv nb mg D) (h : ActiveOK mg num)
    (num2 : Int → Nat) (vertices : List Int)
    (ht : ∀ v ∈ vertices, num2 v ≤ (mg.base_move_indices_involving v).length) :
    ActiveOK (mg.set_active_percentage num2 vertices)
      (fun v => if v ∈ vertices then num2 v else num v) ∧
    (mg.set_active_percentage num2 vertices).Same mg := by
  have hP0 : PairsInv nb mg.clear_updated D := hP.same ⟨rfl, rfl, rfl, rfl⟩
  obtain ⟨t1, t2, t3⟩ := Toggling.update_fold hP0 num2 vertices mg.clear_updated num h.start
    h.current h.bound ht
  generalize hm1 : vertices.foldl (fun m vertex => m.update_vertex (num2 vertex) vertex)
    mg.clear_updated = m1 at t1 t2 t3
  have hP1 : PairsInv nb m1 D := hP0.same t1.same
  have hu : m1.clear_unique.unique_endpoints.OK := by
    have e : m1.unique_endpoints = mg.unique_endpoints := t1.endpoints
    show m1.unique_endpoints.clear.OK
    rw [e]
    exact (SparseIntSet.clear_spec h.endpoints).2.2
  obtain ⟨r1, r2, r3⟩ := MoveGenerators.rebuild_all hP1 m1.vertices_in_updated_moves.elements
    m1.clear_unique ⟨⟨rfl, rfl, rfl, rfl⟩, rfl, rfl, rfl, rfl⟩ hu
  have hres : mg.set_active_percentage num2 vertices =
      m1.vertices_in_updated_moves.elements.foldl (fun m vertex => m.rebuild_vertex vertex)
        m1.clear_unique := by
    unfold MoveGenerators.set_active_percentage
    simp only [hm1]
    rfl
  rw [hres]
  generalize m1.vertices_in_updated_moves.elements.foldl
    (fun m vertex => m.rebuild_vertex vertex) m1.clear_unique = r at r1 r2 r3
  have hc : ∀ v, vertices.foldl (fun c v => upd c v (num2 v)) num v =
      if v ∈ vertices then num2 v else num v := foldl_upd_target num2 vertices num
  refine ⟨⟨fun v => ?_, fun v => ?_, fun v n hn => ?_, ?_, r2, fun v => ?_⟩,
    r1.1.same_trans t1.same⟩
  · rw [r1.2.2.2.1, t2, hc]
  · rw [r1.1.2.2.1, ← hc]
    exact t3 v
  · rw [r1.1.2.2.1] at hn ⊢
    rw [r1.active_in, t1.flags v n hn, hc]
  · rw [r1.2.2.2.2]
    exact t1.updated
  · rw [r3, r1.oriented]
    by_cases c : v ∈ m1.vertices_in_updated_moves.elements
    · rw [if_pos c]
    · rw [if_neg c, t1.oriented_eq hP0 c]
      have e : m1.clear_unique.active_move_indices_involving_1st v =
          mg.active_move_indices_involving_1st v := by
        show m1.active_move_indices_involving_1st v = _
        rw [t1.lists]
        rfl
      rw [e, h.lists v]
      rfl

namespace MoveGenerators

theorem pair_step_activity (I : Instance) (nb : Int → List Int) (mg : MoveGenerators) (i : Int)
    (p : Nat) : (pair_step I nb mg i p).activity = mg.activity := by
  unfold pair_step
  simp only
  split_ifs <;> rfl

theorem pair_fold_activity (I : Instance) (nb : Int → List Int) (i : Int) :
    ∀ (l : List Nat) (mg : MoveGenerators),
      (l.foldl (fun m p => pair_step I nb m i p) mg).activity = mg.activity := by
  intro l
  induction l with
  | nil => intro mg; rfl
  | cons p l ih =>
    intro mg
    rw [List.foldl_cons, ih, pair_step_activity]

theorem pair_loops_activity (I : Instance) (nb : Int → List Int) :
    ∀ (l : List Nat) (mg : MoveGenerators),
      (l.foldl (fun (m : MoveGenerators) (i : Nat) => pair_loop I nb m (i : Int)) mg).activity
        = mg.activity := by
  intro l
  induction l with
  | nil => intro mg; rfl
  | cons p l ih =>
    intro mg
    rw [List.foldl_cons, ih]
    exact pair_fold_activity I nb _ _ mg

theorem create_activity (I : Instance) (nb : Int → List Int) (k : Nat) :
    (create I nb k).activity =
      (fun _ => 0, fun _ => false, fun _ => false, fun _ => [], SparseIntSet.create,
        SparseIntSet.create) := by
  obtain ⟨f, e, _⟩ := sort_loop_spec I (pair_loops I nb (init I k))
  unfold create
  rw [e]
  exact pair_loops_activity I nb _ (init I k)

/-- The registry that the constructor returns has no active move. -/
theorem create_active (I : Instance) (nb : Int → List Int) (k : Nat) :
    ActiveOK (create I nb k) (fun _ => 0) := by
  have h := create_activity I nb k
  unfold activity at h
  simp only [Prod.mk.injEq] at h
  obtain ⟨h1, h2, h3, h4, h5, h6⟩ := h
  refine ⟨fun v => by rw [h1], fun v => Nat.zero_le _, fun v n _ => ?_,
    by rw [h5]; exact SparseIntSet.create_ok, by rw [h6]; exact SparseIntSet.create_ok,
    fun v => ?_⟩
  · unfold is_active_in
    rw [h2, h3]
    simp
  · unfold oriented is_active_in_any
    rw [h4, h2, h3]
    simp

end MoveGenerators

/-- Every registry reached by calls of `set_active_percentage` has the moves and base
indices that the constructor built and satisfies the invariant of the activity data. -/
theorem ActiveReach.active_ok {I : Instance} {nb : Int → List Int} {k : Nat}
    (hnb : NbOK I nb (min k (I.vertices_num - 1))) (hsym : CostSym I) {mg : MoveGenerators}
    {num : Int → Nat} (h : ActiveReach I nb k mg num) :
    mg.Same (MoveGenerators.create I nb k) ∧ ActiveOK mg num := by
  have hP := MoveGenerators.create_inv hnb hsym
  induction h with
  | init => exact ⟨MoveGenerators.Same.same_refl _, MoveGenerators.create_active I nb k⟩
  | step mg num num2 vertices _ hv ih =>
    obtain ⟨s1, a1⟩ := ih
    have hPm := hP.same s1
    obtain ⟨a2, s2⟩ := a1.set_active_percentage hPm num2 vertices (fun v hvin => by
      obtain ⟨v0, vN, vK⟩ := hv v hvin
      rw [s1.2.2.2, (MoveGenerators.create_size I nb k).2.2] at vK
      refine le_trans vK ?_
      rw [s1.2.2.1]
      exact hP.base_length hnb v0 vN (fun q q1 q2 => ⟨v0, vN, q1, q2⟩))
    exact ⟨s2.same_trans s1, a2⟩

/-- The oriented active moves of `v` are the moves in range with first vertex `v` that are
active in one of the two roles. -/
theorem PairsInv.mem_oriented {nb : Int → List Int} {mg : MoveGenerators}
    {D : Int → Nat → Prop} (h : PairsInv nb mg D) (v : Int) (idx : Nat) :
    idx ∈ mg.oriented v ↔
      idx < mg.size ∧ (mg.get idx).1 = v ∧ mg.is_active_in_any idx = true := by
  unfold MoveGenerators.oriented
  rw [List.mem_map]
  constructor
  · rintro ⟨b, hb, e⟩
    rw [List.mem_filter] at hb
    obtain ⟨o1, o2, o3, _, _⟩ := h.orient_spec hb.1
    rw [← e]
    refine ⟨o1, o3, ?_⟩
    have := hb.2
    unfold MoveGenerators.is_active_in_any at this ⊢
    rw [o2]
    simpa using this
  · rintro ⟨h1, h2, h3⟩
    have hl := h.len
    have hsz : mg.size = mg.moves.length := rfl
    obtain ⟨a, c, hac, e1, e2⟩ := h.shape (idx / 2) (by omega)
    have hact : mg.is_active_in_any (2 * (idx / 2)) = true := by
      unfold MoveGenerators.is_active_in_any at h3 ⊢
      have : 2 * (idx / 2) / 2 = idx / 2 := by omega
      rw [this]
      exact h3
    have g1 := MoveGenerators.get_of_getElem? e1
    have g2 := MoveGenerators.get_of_getElem? e2
    refine ⟨2 * (idx / 2), List.mem_filter.2 ⟨(h.base_iff v _).2 ⟨idx / 2, a, c, rfl, e1, ?_⟩,
      by simpa using hact⟩, ?_⟩
    · rcases Nat.mod_two_eq_zero_or_one idx with hpar | hpar
      · have : 2 * (idx / 2) = idx := by omega
        rw [this] at g1
        rw [g1] at h2
        exact Or.inl h2.symm
      · have : 2 * (idx / 2) + 1 = idx := by omega
        rw [this] at g2
        rw [g2] at h2
        exact Or.inr h2.symm
    · unfold MoveGenerators.orient
      rcases Nat.mod_two_eq_zero_or_one idx with hpar | hpar
      · have e : 2 * (idx / 2) = idx := by omega
        rw [e, if_pos h2.symm]
      · have e : 2 * (idx / 2) + 1 = idx := by omega
        rw [e] at g2
        rw [g2] at h2
        have hva : v ≠ (mg.get (2 * (idx / 2))).1 := by
          rw [g1, ← h2]
          exact ne_of_gt hac
        rw [if_neg hva, MoveGenerators.twin_even, e]

theorem PairsInv.oriented_nodup {nb : Int → List Int} {mg : MoveGenerators}
    {D : Int → Nat → Prop} (h : PairsInv nb mg D) (v : Int) :
    ((mg.oriented v).map (fun idx => (mg.get idx).2)).Nodup := by
  unfold MoveGenerators.oriented
  rw [List.map_map]
  refine List.Nodup.map_on ?_ ((h.base_nodup v).filter _)
  intro x hx y hy e
  exact h.orient_inj (List.mem_filter.1 hx).1 (List.mem_filter.1 hy).1 e

/-- The twin of an oriented active move of `v` is an oriented active move of its second
vertex. -/
theorem PairsInv.oriented_twin {nb : Int → List Int} {mg : MoveGenerators}
    {D : Int → Nat → Prop} (h : PairsInv nb mg D) {v j : Int}
    (hex : ∃ idx ∈ mg.oriented v, mg.get idx = (v, j)) :
    ∃ idx ∈ mg.oriented j, mg.get idx = (j, v) := by
  obtain ⟨idx, hin, hg⟩ := hex
  obtain ⟨h1, _, h3⟩ := (h.mem_oriented v idx).1 hin
  have hl := h.len
  have hsz : mg.size = mg.moves.length := rfl
  obtain ⟨a, c, hac, e1, e2⟩ := h.shape (idx / 2) (by omega)
  have g1 := MoveGenerators.get_of_getElem? e1
  have g2 := MoveGenerators.get_of_getElem? e2
  unfold MoveGenerators.is_active_in_any at h3
  rcases Nat.mod_two_eq_zero_or_one idx with hpar | hpar
  · have e : 2 * (idx / 2) = idx := by omega
    rw [e] at g1
    rw [g1] at hg
    have hv : a = v := congrArg Prod.fst hg
    have hj : c = j := congrArg Prod.snd hg
    refine ⟨2 * (idx / 2) + 1, (h.mem_oriented j _).2 ⟨by omega, by rw [g2, hj], ?_⟩,
      by rw [g2, hv, hj]⟩
    unfold MoveGenerators.is_active_in_any
    have : (2 * (idx / 2) + 1) / 2 = idx / 2 := by omega
    rw [this]
    exact h3
  · have e : 2 * (idx / 2) + 1 = idx := by omega
    rw [e] at g2
    rw [g2] at hg
    have hv : c = v := congrArg Prod.fst hg
    have hj : a = j := congrArg Prod.snd hg
    refine ⟨2 * (idx / 2), (h.mem_oriented j _).2 ⟨by omega, by rw [g1, hj], ?_⟩,
      by rw [g1, hv, hj]⟩
    unfold MoveGenerators.is_active_in_any
    have : 2 * (idx / 2) / 2 = idx / 2 := by omega
    rw [this]
    exact h3

/-- A base move is active in one of its roles exactly when one of its two flags is set. -/
theorem PairsInv.any_iff {nb : Int → List Int} {mg : MoveGenerators}
    {D : Int → Nat → Prop} (h : PairsInv nb mg D) {v : Int} {b : Nat}
    (hb : b ∈ mg.base_move_indices_involving v) :
    mg.is_active_in_any b = true ↔
      (mg.is_active_in b (mg.get b).1 = true ∨ mg.is_active_in b (mg.get b).2 = true) := by
  obtain ⟨_, _, _, hlt, _, _⟩ := h.base_mem hb
  unfold MoveGenerators.is_active_in_any MoveGenerators.is_active_in
  rw [if_pos rfl, if_neg (ne_of_gt hlt)]
  simp

/-- A base move of `v` is active in the role of `v` exactly when it is among the first
`num v` base indices of `v`. -/
theorem ActiveOK.role_iff {nb : Int → List Int} {mg : MoveGenerators} {D : Int → Nat → Prop}
    {num : Int → Nat} (hP : PairsInv nb mg D) (h : ActiveOK mg num) {v : Int} {b : Nat}
    (hb : b ∈ mg.base_move_indices_involving v) :
    mg.is_active_in b v = true ↔
      ∃ n, n < num v ∧ (mg.base_move_indices_involving v)[n]? = some b := by
  obtain ⟨n0, hn0, e0⟩ := List.getElem_of_mem hb
  have hfl := h.flags v n0 hn0
  rw [List.getD_eq_getElem _ 0 hn0, e0] at hfl
  rw [hfl]
  constructor
  · intro hlt
    exact ⟨n0, hlt, by rw [List.getElem?_eq_getElem hn0, e0]⟩
  · rintro ⟨n, hn, e⟩
    obtain ⟨hn2, e2⟩ := List.getElem?_eq_some.1 e
    have : n = n0 := (List.Nodup.getElem_inj_iff (hP.base_nodup v)).1 (e2.trans e0.symm)
    rw [← this]
    exact hn

/-! ## OneOneExchange -/

section Exchange

variable {I : Instance} {s : Solution} {A : Nat → List Int}

/-- The links and the cached cost at two consecutive vertices of a route. -/
theorem RouteRep.adjacent {r : Nat} {l : List Int} (h : RouteRep I s r l) {x y : Int}
    {t : List Int} (hr : l ~r (x :: y :: t)) :
    s.get_next_vertex r x = y ∧ s.get_prev_vertex r y = x ∧
    s.get_cost_prev_vertex r y = I.cost x y ∧ s.get_prev_vertex r x = lastFrom y t ∧
    s.get_cost_prev_vertex r x = I.cost (lastFrom y t) x := by
  have h2 := RouteRep_isRotated hr h
  obtain ⟨a1, a2, a3, _, _, a6, a7⟩ := IsCycle_head (h2.cycle (by simp))
  exact ⟨a1, a2, a3, a6, a7⟩

/-- A customer that is in no route has the dummy route as its route. -/
theorem Rep.absent_ptr (hR : Rep I s A) {v : Int} (hv : v ≠ 0) (hno : ∀ r, v ∉ A r) :
    (s.customers_list v).route_ptr = 0 := by
  by_contra hne
  exact hno _ (((hR.routes _).mem_iff v hv).2 ⟨rfl, hne⟩)

/-- A customer is in the route of its route pointer only. -/
theorem Rep.route_of_mem (hR : Rep I s A) {v : Int} (hv : v ≠ 0) {r : Nat} (hin : v ∈ A r) :
    (s.customers_list v).route_ptr = r ∧ r ≠ 0 :=
  ((hR.routes r).mem_iff v hv).1 hin

/-- The shape of a cycle around `i` and `j` when `i` is not the predecessor `p` of `j` and
`p` is not the successor of `i`. -/
theorem cycle_shape {cost : Int → Int → Int} {nx pv cc : Int → Int} {l : List Int}
    (hc : IsCycle cost nx pv cc l) {i j : Int} (hi : i ∈ l) (hj : j ∈ l) (hij : i ≠ j)
    (h1 : i ≠ pv j) (h2 : pv j ≠ nx i) :
    ∃ X Y, l ~r (i :: nx i :: (X ++ pv j :: j :: Y)) := by
  obtain ⟨T, hT⟩ := exists_rotated_cons hi
  have hc2 := IsCycle_isRotated hT hc
  have hjT : j ∈ T := by
    have := hT.mem_iff.1 hj
    rcases List.mem_cons.1 this with e | e
    · exact absurd e.symm hij
    · exact e
  obtain ⟨T1, Y, rfl⟩ := List.append_of_mem hjT
  rcases List.eq_nil_or_concat T1 with e | ⟨T2, p, e⟩
  · subst e
    obtain ⟨_, a2, _⟩ := IsCycle_head (show IsCycle cost nx pv cc (i :: j :: Y) from hc2)
    exact absurd a2.symm h1
  · rw [List.concat_eq_append] at e
    subst e
    have hrot : (i :: (T2 ++ [p] ++ j :: Y)) ~r (p :: j :: (Y ++ i :: T2)) := by
      have := @List.isRotated_append _ (i :: T2) (p :: j :: Y)
      simpa using this
    obtain ⟨_, b2, _⟩ := IsCycle_head (IsCycle_isRotated hrot hc2)
    cases T2 with
    | nil =>
      obtain ⟨c1, _⟩ := IsCycle_head (show IsCycle cost nx pv cc (i :: p :: j :: Y) from hc2)
      exact absurd (b2.trans c1.symm) h2
    | cons n X =>
      obtain ⟨c1, _⟩ := IsCycle_head
        (show IsCycle cost nx pv cc (i :: n :: (X ++ [p] ++ j :: Y)) from hc2)
      refine ⟨X, Y, ?_⟩
      rw [c1, b2]
      simpa using hT

end Exchange

section Exchange2

variable {I : Instance} {s : Solution} {A : Nat → List Int}

/-- A customer of route `r` that is not in the new list of `r` is in no route of a family
that agrees with `A` wherever it holds the customer. -/
theorem not_mem_routes (hR : Rep I s A) {v : Int} (hv0 : v ≠ 0) {r : Nat} (hv : v ∈ A r)
    (B : Nat → List Int) (hB : ∀ r2, B r2 = A r2 ∨ v ∉ B r2) (hBr : v ∉ B r) :
    ∀ r2, v ∉ B r2 := by
  intro r2 hin
  rcases hB r2 with e | e
  · rw [e] at hin
    have h1 := (hR.route_of_mem hv0 hin).1
    have h2 := (hR.route_of_mem hv0 hv).1
    have : r2 = r := h1.symm.trans h2
    rw [this] at hin e
    exact hBr (e ▸ hin)
  · exact e hin

/-- The four calls of `execute` when `i` and `j` are in the same route `r`: the vertices
`i` and `jP`, the predecessor of `j`, change places. -/
theorem exchange_intra (hR : Rep I s A) (hC : CostOK I s A) {r : Nat} {i iN jP j : Int}
    {X Y : List Int} (hA : A r ~r (i :: iN :: (X ++ jP :: j :: Y))) :
    Rep I (Solution.insert_vertex_before I (Solution.remove_vertex I
        (Solution.insert_vertex_before I (Solution.remove_vertex I s true r i).1 true r j i)
        true r jP).1 true r iN jP) (upd A r (jP :: iN :: (X ++ i :: j :: Y))) ∧
    CostOK I (Solution.insert_vertex_before I (Solution.remove_vertex I
        (Solution.insert_vertex_before I (Solution.remove_vertex I s true r i).1 true r j i)
        true r jP).1 true r iN jP) (upd A r (jP :: iN :: (X ++ i :: j :: Y))) ∧
    (Solution.insert_vertex_before I (Solution.remove_vertex I
        (Solution.insert_vertex_before I (Solution.remove_vertex I s true r i).1 true r j i)
        true r jP).1 true r iN jP).solution_cost =
      s.solution_cost + (cycCost I.cost (jP :: iN :: (X ++ i :: j :: Y)) -
        cycCost I.cost (i :: iN :: (X ++ jP :: j :: Y))) := by
  have hrr := RouteRep_isRotated hA (hR.routes r)
  have hnd := hrr.nodup
  have hrg := hrr.range
  have hiA : i ∈ A r := hA.mem_iff.2 (by simp)
  have hjPA : jP ∈ A r := hA.mem_iff.2 (by simp)
  -- remove `i`
  obtain ⟨R1, e1⟩ := remove_vertex_ok true hR hA (by simp)
  obtain ⟨_, C1, _, _⟩ := remove_vertex_ok2 true hR hC hA (by simp)
  -- insert `i` before `j`
  have rot2 : upd A r (iN :: (X ++ jP :: j :: Y)) r ~r (j :: (Y ++ iN :: (X ++ [jP]))) := by
    rw [upd_same]
    have := @List.isRotated_append _ (iN :: (X ++ [jP])) (j :: Y)
    simpa using this
  have hi2 : i ∉ upd A r (iN :: (X ++ jP :: j :: Y)) r := by
    rw [upd_same]
    exact (List.nodup_cons.1 hnd).1
  have hp2 : i ≠ 0 → ((Solution.remove_vertex I s true r i).1.customers_list i).route_ptr = 0 :=
    fun h0 => R1.absent_ptr h0 (not_mem_routes hR h0 hiA _ (fun r2 => by
      by_cases e : r2 = r
      · rw [e]; exact Or.inr hi2
      · exact Or.inl (upd_other _ _ _ _ e)) hi2)
  obtain ⟨R2, e2⟩ := insert_vertex_ok true R1 rot2 hi2 hp2 (hrg i (by simp))
  obtain ⟨_, C2, _, _⟩ := insert_vertex_ok2 true R1 C1 rot2 hi2 hp2 (hrg i (by simp))
  rw [upd_upd] at R2 C2
  -- remove `jP`
  have rot3 : upd A r (i :: j :: (Y ++ iN :: (X ++ [jP]))) r ~r
      (jP :: i :: j :: (Y ++ iN :: X)) := by
    rw [upd_same]
    have := @List.isRotated_append _ (i :: j :: (Y ++ iN :: X)) [jP]
    simpa using this
  obtain ⟨R3, e3⟩ := remove_vertex_ok true R2 rot3 (by simp)
  obtain ⟨_, C3, _, _⟩ := remove_vertex_ok2 true R2 C2 rot3 (by simp)
  rw [upd_upd] at R3 C3
  -- insert `jP` before `iN`
  have rot4 : upd A r (i :: j :: (Y ++ iN :: X)) r ~r (iN :: (X ++ i :: j :: Y)) := by
    rw [upd_same]
    have := @List.isRotated_append _ (i :: j :: Y) (iN :: X)
    simpa using this
  have hjP4 : jP ∉ upd A r (i :: j :: (Y ++ iN :: X)) r := by
    rw [upd_same]
    exact (List.nodup_cons.1 (RouteRep_isRotated rot3 (R2.routes r)).nodup).1
  have hp4 : jP ≠ 0 → ((Solution.remove_vertex I (Solution.insert_vertex_before I
      (Solution.remove_vertex I s true r i).1 true r j i) true r jP).1.customers_list
        jP).route_ptr = 0 :=
    fun h0 => R3.absent_ptr h0 (not_mem_routes hR h0 hjPA _ (fun r2 => by
      by_cases e : r2 = r
      · rw [e]; exact Or.inr hjP4
      · exact Or.inl (upd_other _ _ _ _ e)) hjP4)
  obtain ⟨R4, e4⟩ := insert_vertex_ok true R3 rot4 hjP4 hp4 (hrg jP (by simp))
  obtain ⟨_, C4, _, _⟩ := insert_vertex_ok2 true R3 C3 rot4 hjP4 hp4 (hrg jP (by simp))
  rw [upd_upd] at R4 C4
  refine ⟨R4, C4, ?_⟩
  rw [upd_same] at rot2 rot3 rot4
  have q2 := @cycCost_isRotated I.cost _ _ rot2
  have q3 := @cycCost_isRotated I.cost _ _ rot3
  have q4 := @cycCost_isRotated I.cost _ _ rot4
  rw [e4, e3, e2, e1]
  omega

end Exchange2

section Exchange3

variable {I : Instance} {s : Solution} {A : Nat → List Int}

/-- The four calls of `execute` when the customer `i` is in route `ri` and `j`, with a
customer `jP` as its predecessor, in another route `rj`: `i` and `jP` change places. -/
theorem exchange_inter (hR : Rep I s A) (hC : CostOK I s A) {ri rj : Nat} (hne : ri ≠ rj)
    {i iN jP j : Int} {P Q : List Int} (hi0 : i ≠ 0) (hjP0 : jP ≠ 0)
    (hAi : A ri ~r (i :: iN :: P)) (hAj : A rj ~r (jP :: j :: Q)) :
    Rep I (Solution.insert_vertex_before I (Solution.remove_vertex I
        (Solution.insert_vertex_before I (Solution.remove_vertex I s true ri i).1 true rj j i)
        true rj jP).1 true ri iN jP)
      (upd (upd (upd A ri (iN :: P)) rj (i :: j :: Q)) ri (jP :: iN :: P)) ∧
    CostOK I (Solution.insert_vertex_before I (Solution.remove_vertex I
        (Solution.insert_vertex_before I (Solution.remove_vertex I s true ri i).1 true rj j i)
        true rj jP).1 true ri iN jP)
      (upd (upd (upd A ri (iN :: P)) rj (i :: j :: Q)) ri (jP :: iN :: P)) ∧
    (Solution.insert_vertex_before I (Solution.remove_vertex I
        (Solution.insert_vertex_before I (Solution.remove_vertex I s true ri i).1 true rj j i)
        true rj jP).1 true ri iN jP).solution_cost =
      s.solution_cost +
        (cycCost I.cost (jP :: iN :: P) - cycCost I.cost (i :: iN :: P)) +
        (cycCost I.cost (i :: j :: Q) - cycCost I.cost (jP :: j :: Q)) := by
  have hri := RouteRep_isRotated hAi (hR.routes ri)
  have hrj := RouteRep_isRotated hAj (hR.routes rj)
  have hiA : i ∈ A ri := hAi.mem_iff.2 (by simp)
  have hjPA : jP ∈ A rj := hAj.mem_iff.2 (by simp)
  have hi_rj : i ∉ A rj := fun h =>
    hne ((hR.route_of_mem hi0 hiA).1.symm.trans (hR.route_of_mem hi0 h).1)
  have hjP_ri : jP ∉ A ri := fun h =>
    hne ((hR.route_of_mem hjP0 h).1.symm.trans (hR.route_of_mem hjP0 hjPA).1)
  have hne2 : rj ≠ ri := fun e => hne e.symm
  -- remove `i`
  obtain ⟨R1, e1⟩ := remove_vertex_ok true hR hAi (by simp)
  obtain ⟨_, C1, _, _⟩ := remove_vertex_ok2 true hR hC hAi (by simp)
  -- insert `i` before `j`
  have rot2 : upd A ri (iN :: P) rj ~r (j :: (Q ++ [jP])) := by
    rw [upd_other _ _ _ _ hne2]
    refine hAj.trans ?_
    have := @List.isRotated_append _ [jP] (j :: Q)
    simpa using this
  have hi2 : i ∉ upd A ri (iN :: P) rj := by
    rw [upd_other _ _ _ _ hne2]
    exact hi_rj
  have hi1 : i ∉ upd A ri (iN :: P) ri := by
    rw [upd_same]
    exact (List.nodup_cons.1 hri.nodup).1
  have hp2 : i ≠ 0 → ((Solution.remove_vertex I s true ri i).1.customers_list i).route_ptr = 0 :=
    fun h0 => R1.absent_ptr h0 (not_mem_routes hR h0 hiA _ (fun r2 => by
      by_cases e : r2 = ri
      · rw [e]; exact Or.inr hi1
      · exact Or.inl (upd_other _ _ _ _ e)) hi1)
  obtain ⟨R2, e2⟩ := insert_vertex_ok true R1 rot2 hi2 hp2 (hri.range i (by simp))
  obtain ⟨_, C2, _, _⟩ := insert_vertex_ok2 true R1 C1 rot2 hi2 hp2 (hri.range i (by simp))
  -- remove `jP`
  have rot3 : upd (upd A ri (iN :: P)) rj (i :: j :: (Q ++ [jP])) rj ~r
      (jP :: i :: j :: Q) := by
    rw [upd_same]
    have := @List.isRotated_append _ (i :: j :: Q) [jP]
    simpa using this
  obtain ⟨R3, e3⟩ := remove_vertex_ok true R2 rot3 (by simp)
  obtain ⟨_, C3, _, _⟩ := remove_vertex_ok2 true R2 C2 rot3 (by simp)
  rw [upd_upd] at R3 C3
  -- insert `jP` before `iN`
  have rot4 : upd (upd A ri (iN :: P)) rj (i :: j :: Q) ri ~r (iN :: P) := by
    rw [upd_other _ _ _ _ hne, upd_same]
  have hP : jP ∉ iN :: P := fun h => hjP_ri (hAi.mem_iff.2 (List.mem_cons_of_mem i h))
  have hjP4 : jP ∉ upd (upd A ri (iN :: P)) rj (i :: j :: Q) ri := by
    rw [upd_other _ _ _ _ hne, upd_same]
    exact hP
  have hjP3 : jP ∉ upd (upd A ri (iN :: P)) rj (i :: j :: Q) rj := by
    rw [upd_same]
    exact (List.nodup_cons.1 (RouteRep_isRotated rot3 (R2.routes rj)).nodup).1
  have hp4 : jP ≠ 0 → ((Solution.remove_vertex I (Solution.insert_vertex_before I
      (Solution.remove_vertex I s true ri i).1 true rj j i) true rj jP).1.customers_list
        jP).route_ptr = 0 :=
    fun h0 => R3.absent_ptr h0 (not_mem_routes hR h0 hjPA _ (fun r2 => by
      by_cases e : r2 = rj
      · rw [e]; exact Or.inr hjP3
      · by_cases e2 : r2 = ri
        · rw [e2]; exact Or.inr hjP4
        · exact Or.inl ((upd_other _ _ _ _ e).trans (upd_other _ _ _ _ e2))) hjP3)
  obtain ⟨R4, e4⟩ := insert_vertex_ok true R3 rot4 hjP4 hp4 (hrj.range jP (by simp))
  obtain ⟨_, C4, _, _⟩ := insert_vertex_ok2 true R3 C3 rot4 hjP4 hp4 (hrj.range jP (by simp))
  refine ⟨R4, C4, ?_⟩
  have q2 : cycCost I.cost (j :: (Q ++ [jP])) = cycCost I.cost (jP :: j :: Q) := by
    apply cycCost_isRotated
    have := @List.isRotated_append _ [jP] (j :: Q)
    simpa using this
  have q3 : cycCost I.cost (jP :: i :: j :: Q) = cycCost I.cost (i :: j :: (Q ++ [jP])) := by
    apply cycCost_isRotated
    have := @List.isRotated_append _ (i :: j :: Q) [jP]
    simpa using this
  rw [e4, e3, e2, e1]
  omega

end Exchange3

theorem swap_cost_intra (c : Int → Int → Int) (i iN jP j : Int) (X Y : List Int) :
    cycCost c (jP :: iN :: (X ++ i :: j :: Y)) - cycCost c (i :: iN :: (X ++ jP :: j :: Y)) =
      c (lastFrom iN X) i + c i j + (c (lastFrom j Y) jP + c jP iN) +
        (-c (lastFrom j Y) i - c i iN) + (-c (lastFrom iN X) jP - c jP j) := by
  rw [cycCost_head, cycCost_head]
  simp only [segCost_append, lastFrom_append, lastFrom_cons, segCost_cons]
  ring

theorem swap_cost_inter (c : Int → Int → Int) (i iN jP j : Int) (P Q : List Int) :
    (cycCost c (jP :: iN :: P) - cycCost c (i :: iN :: P)) +
      (cycCost c (i :: j :: Q) - cycCost c (jP :: j :: Q)) =
      c (lastFrom j Q) i + c i j + (c (lastFrom iN P) jP + c jP iN) +
        (-c (lastFrom iN P) i - c i iN) + (-c (lastFrom j Q) jP - c jP j) := by
  rw [cycCost_head, cycCost_head, cycCost_head, cycCost_head]
  ring

section Exchange4

variable {I : Instance} {s : Solution} {A : Nat → List Int}

/-- The value of `compute_cost` when `i` and `j` are in the same route. -/
theorem compute_cost_intra (hR : Rep I s A) {r : Nat} {i iN jP j : Int} {X Y : List Int}
    (hri : s.get_route_index_fallback i j = r) (hrj : s.get_route_index_fallback j i = r)
    (hA : A r ~r (i :: iN :: (X ++ jP :: j :: Y))) :
    s.get_next_vertex r i = iN ∧ s.get_prev_vertex r j = jP ∧
    s.get_prev_vertex r i = lastFrom j Y ∧ s.get_prev_vertex r jP = lastFrom iN X ∧
    OneOneExchange.compute_cost I s i j =
      cycCost I.cost (jP :: iN :: (X ++ i :: j :: Y)) -
        cycCost I.cost (i :: iN :: (X ++ jP :: j :: Y)) := by
  obtain ⟨a1, _, a3, a4, a5⟩ := (hR.routes r).adjacent hA
  have hrot : A r ~r (jP :: j :: (Y ++ i :: iN :: X)) := by
    refine hA.trans ?_
    have := @List.isRotated_append _ (i :: iN :: X) (jP :: j :: Y)
    simpa using this
  obtain ⟨_, b2, b3, b4, b5⟩ := (hR.routes r).adjacent hrot
  simp only [lastFrom_append, lastFrom_cons] at a4 a5 b4 b5
  refine ⟨a1, b2, a4, b4, ?_⟩
  rw [swap_cost_intra]
  unfold OneOneExchange.compute_cost
  simp only [hri, hrj, a1, b2, a3, a4, a5, b3, b4, b5]

/-- The value of `compute_cost` when `i` and `j` are in different routes. -/
theorem compute_cost_inter (hR : Rep I s A) {ri rj : Nat} {i iN jP j : Int} {P Q : List Int}
    (hri : s.get_route_index_fallback i j = ri) (hrj : s.get_route_index_fallback j i = rj)
    (hAi : A ri ~r (i :: iN :: P)) (hAj : A rj ~r (jP :: j :: Q)) :
    s.get_next_vertex ri i = iN ∧ s.get_prev_vertex rj j = jP ∧
    s.get_prev_vertex ri i = lastFrom iN P ∧ s.get_prev_vertex rj jP = lastFrom j Q ∧
    OneOneExchange.compute_cost I s i j =
      (cycCost I.cost (jP :: iN :: P) - cycCost I.cost (i :: iN :: P)) +
        (cycCost I.cost (i :: j :: Q) - cycCost I.cost (jP :: j :: Q)) := by
  obtain ⟨a1, _, a3, a4, a5⟩ := (hR.routes ri).adjacent hAi
  obtain ⟨_, b2, b3, b4, b5⟩ := (hR.routes rj).adjacent hAj
  refine ⟨a1, b2, a4, b4, ?_⟩
  rw [swap_cost_inter]
  unfold OneOneExchange.compute_cost
  simp only [hri, hrj, a1, b2, a3, a4, a5, b3, b4, b5]

end Exchange4

section Exchange5

variable {I : Instance} {s : Solution} {A : Nat → List Int}

/-- The routes of the endpoints of a move hold them. -/
theorem endpoints_mem (hR : Rep I s A) (hdep : ∀ r, A r ≠ [] → (0 : Int) ∈ A r) {i j : Int}
    (hij : i ≠ j) (hi : i ≠ 0 → (s.customers_list i).route_ptr ≠ 0)
    (hj : j ≠ 0 → (s.customers_list j).route_ptr ≠ 0) :
    i ∈ A (s.get_route_index_fallback i j) ∧ j ∈ A (s.get_route_index_fallback j i) := by
  have key : ∀ a b : Int, a ≠ b → (a ≠ 0 → (s.customers_list a).route_ptr ≠ 0) →
      (b ≠ 0 → (s.customers_list b).route_ptr ≠ 0) →
      a ∈ A (s.get_route_index_fallback a b) := by
    intro a b hab ha hb
    unfold Solution.get_route_index_fallback
    by_cases a0 : a = 0
    · rw [if_pos a0]
      have b0 : b ≠ 0 := fun e => hab (a0.trans e.symm)
      have hbin : b ∈ A (s.customers_list b).route_ptr :=
        ((hR.routes _).mem_iff b b0).2 ⟨rfl, hb b0⟩
      rw [a0]
      exact hdep _ (List.ne_nil_of_mem hbin)
    · rw [if_neg a0]
      exact ((hR.routes _).mem_iff a a0).2 ⟨rfl, ha a0⟩
  exact ⟨key i j hij hi hj, key j i (fun e => hij e.symm) hj hi⟩

/-- The shape of the routes of a feasible move: either `i` and `j` are in one route, in
which `i`, its successor, the predecessor of `j` and `j` are four vertices in this cyclic
order, or `i` and the predecessor of `j` are customers of two routes. -/
theorem exchange_shape (hR : Rep I s A) (hdep : ∀ r, A r ≠ [] → (0 : Int) ∈ A r) {i j : Int}
    (hij : i ≠ j) (hi : i ≠ 0 → (s.customers_list i).route_ptr ≠ 0)
    (hj : j ≠ 0 → (s.customers_list j).route_ptr ≠ 0)
    (hf : OneOneExchange.is_feasible I s i j = true) :
    (s.get_route_index_fallback i j = s.get_route_index_fallback j i ∧
      ∃ X Y, A (s.get_route_index_fallback i j) ~r
        (i :: s.get_next_vertex (s.get_route_index_fallback i j) i ::
          (X ++ s.get_prev_vertex (s.get_route_index_fallback j i) j :: j :: Y))) ∨
    (s.get_route_index_fallback i j ≠ s.get_route_index_fallback j i ∧ i ≠ 0 ∧
      s.get_prev_vertex (s.get_route_index_fallback j i) j ≠ 0 ∧
      ∃ P Q, A (s.get_route_index_fallback i j) ~r
          (i :: s.get_next_vertex (s.get_route_index_fallback i j) i :: P) ∧
        A (s.get_route_index_fallback j i) ~r
          (s.get_prev_vertex (s.get_route_index_fallback j i) j :: j :: Q)) := by
  obtain ⟨hiA, hjA⟩ := endpoints_mem hR hdep hij hi hj
  unfold OneOneExchange.is_feasible at hf
  simp only [Bool.or_eq_true, Bool.and_eq_true, decide_eq_true_eq,
    Solution.get_route_load] at hf
  generalize hri : s.get_route_index_fallback i j = ri at *
  generalize hrj : s.get_route_index_fallback j i = rj at *
  by_cases hsame : ri = rj
  · left
    refine ⟨hsame, ?_⟩
    rcases hf with hf | hf
    · exact absurd hsame hf.1.1.1
    · subst hsame
      exact cycle_shape ((hR.routes ri).cycle (List.ne_nil_of_mem hiA)) hiA hjA hij hf.1.2 hf.2
  · right
    rcases hf with hf | hf
    · have hjP0 := hf.1.1.2
      have hi0 : i ≠ 0 := by
        intro e
        apply hsame
        have j0 : j ≠ 0 := fun e2 => hij (e.trans e2.symm)
        rw [← hri, ← hrj]
        unfold Solution.get_route_index_fallback
        rw [if_pos e, if_neg j0]
      refine ⟨hsame, hi0, hjP0, ?_⟩
      -- the route of `i`
      obtain ⟨T, hT⟩ := exists_rotated_cons hiA
      have h0T : (0 : Int) ∈ T := by
        have := hT.mem_iff.1 (hdep ri (List.ne_nil_of_mem hiA))
        rcases List.mem_cons.1 this with e | e
        · exact absurd e.symm hi0
        · exact e
      obtain ⟨n, P, rfl⟩ := List.exists_cons_of_ne_nil (List.ne_nil_of_mem h0T)
      obtain ⟨c1, _⟩ := ((hR.routes ri).adjacent hT)
      -- the route of `j`
      have hcj := (hR.routes rj).cycle (List.ne_nil_of_mem hjA)
      obtain ⟨_, f2, _, f4, _⟩ := IsCycle_facts hcj j hjA
      obtain ⟨T2, hT2⟩ := exists_rotated_cons f4
      have hne2 : T2 ≠ [] := by
        intro e
        rw [e] at hT2
        have := hT2.mem_iff.1 (hdep rj (List.ne_nil_of_mem hjA))
        simp at this
        exact hjP0 this.symm
      obtain ⟨y, Q, rfl⟩ := List.exists_cons_of_ne_nil hne2
      obtain ⟨d1, _⟩ := ((hR.routes rj).adjacent hT2)
      have hy : y = j := d1.symm.trans f2
      rw [hy] at hT2
      rw [c1]
      exact ⟨P, Q, hT, hT2⟩
    · exact absurd hf.1.1 hsame

end Exchange5

theorem map_swap_fix (a b : Int) (l : List Int) (ha : a ∉ l) (hb : b ∉ l) :
    l.map (fun v => if v = a then b else if v = b then a else v) = l := by
  induction l with
  | nil => rfl
  | cons x t ih =>
    have hxa : x ≠ a := fun e => ha (by simp [e])
    have hxb : x ≠ b := fun e => hb (by simp [e])
    rw [List.map_cons, ih (fun h => ha (List.mem_cons_of_mem x h))
      (fun h => hb (List.mem_cons_of_mem x h))]
    simp [hxa, hxb]

theorem map_swap_intra {i iN jP j : Int} {X Y : List Int}
    (hnd : (i :: iN :: (X ++ jP :: j :: Y)).Nodup) :
    (i :: iN :: (X ++ jP :: j :: Y)).map (fun v => if v = i then jP else if v = jP then i else v)
      = jP :: iN :: (X ++ i :: j :: Y) := by
  simp only [List.nodup_cons, List.mem_cons, List.mem_append, List.nodup_append, not_or,
    List.disjoint_cons_right] at hnd
  obtain ⟨⟨h1, h2, h3, h4, h5⟩, ⟨_, g3, _, _⟩, _, ⟨⟨m1, m2⟩, _, _⟩, k4, _, _⟩ := hnd
  have e1 : X.map (fun v => if v = i then jP else if v = jP then i else v) = X :=
    map_swap_fix i jP X h2 k4
  have e2 : Y.map (fun v => if v = i then jP else if v = jP then i else v) = Y :=
    map_swap_fix i jP Y h5 m2
  simp only [List.map_cons, List.map_append, e1, e2, if_true]
  have n1 : iN ≠ i := fun e => h1 e.symm
  have n3 : jP ≠ i := fun e => h3 e.symm
  have n4 : j ≠ i := fun e => h4 e.symm
  have n5 : j ≠ jP := fun e => m1 e.symm
  simp [n1, g3, n3, n4, n5]

theorem map_swap_head {a b : Int} {t : List Int} (hnd : (a :: t).Nodup) (hb : b ∉ t) :
    (a :: t).map (fun v => if v = a then b else if v = b then a else v) = b :: t := by
  rw [List.map_cons, map_swap_fix a b t (List.nodup_cons.1 hnd).1 hb]
  simp

theorem map_swap_head2 {a b : Int} {t : List Int} (hnd : (b :: t).Nodup) (ha : a ∉ t) :
    (b :: t).map (fun v => if v = a then b else if v = b then a else v) = a :: t := by
  rw [List.map_cons, map_swap_fix a b t ha (List.nodup_cons.1 hnd).1]
  by_cases e : b = a
  · simp [e]
  · simp [e]

section Exchange6

variable {I : Instance} {s : Solution} {A : Nat → List Int}

/-- A feasible move executed on a consistent solution: the solution stays consistent, `i`
and the predecessor of `j` have changed places, and the stored cost has changed by
`compute_cost`. -/
theorem execute_spec (hR : Rep I s A) (hC : CostOK I s A)
    (hdep : ∀ r, A r ≠ [] → (0 : Int) ∈ A r) {i j : Int} (hij : i ≠ j)
    (hi : i ≠ 0 → (s.customers_list i).route_ptr ≠ 0)
    (hj : j ≠ 0 → (s.customers_list j).route_ptr ≠ 0)
    (hf : OneOneExchange.is_feasible I s i j = true) :
    ∃ B, Rep I (OneOneExchange.execute I s i j) B ∧
      CostOK I (OneOneExchange.execute I s i j) B ∧ (∀ r, B r ≠ [] → (0 : Int) ∈ B r) ∧
      (∀ r, B r ~r
        (if r = s.get_route_index_fallback i j ∨ r = s.get_route_index_fallback j i then
          (A r).map (fun v =>
            if v = i then s.get_prev_vertex (s.get_route_index_fallback j i) j
            else if v = s.get_prev_vertex (s.get_route_index_fallback j i) j then i else v)
        else A r)) ∧
      (OneOneExchange.execute I s i j).solution_cost =
        s.solution_cost + OneOneExchange.compute_cost I s i j := by
  have hshape := exchange_shape hR hdep hij hi hj hf
  unfold OneOneExchange.execute
  simp only
  generalize hri : s.get_route_index_fallback i j = ri at hshape ⊢
  generalize hrj : s.get_route_index_fallback j i = rj at hshape ⊢
  generalize hiN : s.get_next_vertex ri i = iN at hshape ⊢
  generalize hjP : s.get_prev_vertex rj j = jP at hshape ⊢
  rcases hshape with ⟨hsame, X, Y, hA⟩ | ⟨hne, hi0, hjP0, P, Q, hAi, hAj⟩
  · subst hsame
    obtain ⟨R4, C4, e4⟩ := exchange_intra hR hC hA
    obtain ⟨_, _, _, _, hcc⟩ := compute_cost_intra hR hri hrj hA
    have hnd := (RouteRep_isRotated hA (hR.routes ri)).nodup
    refine ⟨_, R4, C4, fun r hr => ?_, fun r => ?_, by rw [e4, hcc]⟩
    · by_cases e : r = ri
      · rw [e, upd_same]
        have h0 := hA.mem_iff.1 (hdep ri ((isRotated_ne_nil hA).2 (by simp)))
        simp only [List.mem_cons, List.mem_append] at h0 ⊢
        tauto
      · rw [upd_other _ _ _ _ e] at hr ⊢
        exact hdep r hr
    · by_cases e : r = ri
      · rw [e, upd_same, if_pos (Or.inl rfl), ← map_swap_intra hnd]
        exact (hA.map _).symm
      · rw [upd_other _ _ _ _ e, if_neg (by simp [e])]
  · obtain ⟨R4, C4, e4⟩ := exchange_inter hR hC hne hi0 hjP0 hAi hAj
    obtain ⟨_, _, _, _, hcc⟩ := compute_cost_inter hR hri hrj hAi hAj
    have hndi := (RouteRep_isRotated hAi (hR.routes ri)).nodup
    have hndj := (RouteRep_isRotated hAj (hR.routes rj)).nodup
    have hiA : i ∈ A ri := hAi.mem_iff.2 (by simp)
    have hjPA : jP ∈ A rj := hAj.mem_iff.2 (by simp)
    have hi_rj : i ∉ A rj := fun h =>
      hne ((hR.route_of_mem hi0 hiA).1.symm.trans (hR.route_of_mem hi0 h).1)
    have hjP_ri : jP ∉ A ri := fun h =>
      hne ((hR.route_of_mem hjP0 h).1.symm.trans (hR.route_of_mem hjP0 hjPA).1)
    have hne2 : rj ≠ ri := fun e => hne e.symm
    refine ⟨_, R4, C4, fun r hr => ?_, fun r => ?_, by rw [e4, hcc]; ring⟩
    · by_cases e : r = ri
      · rw [e, upd_same]
        have h0 := hAi.mem_iff.1 (hdep ri ((isRotated_ne_nil hAi).2 (by simp)))
        simp only [List.mem_cons] at h0 ⊢
        rcases h0 with h0 | h0 | h0
        · exact absurd h0.symm hi0
        · exact Or.inr (Or.inl h0)
        · exact Or.inr (Or.inr h0)
      · rw [upd_other _ _ _ _ e] at hr ⊢
        by_cases e2 : r = rj
        · rw [e2, upd_same]
          have h0 := hAj.mem_iff.1 (hdep rj ((isRotated_ne_nil hAj).2 (by simp)))
          simp only [List.mem_cons] at h0 ⊢
          rcases h0 with h0 | h0 | h0
          · exact absurd h0.symm hjP0
          · exact Or.inr (Or.inl h0)
          · exact Or.inr (Or.inr h0)
        · rw [upd_other _ _ _ _ e2, upd_other _ _ _ _ e] at hr ⊢
          exact hdep r hr
    · by_cases e : r = ri
      · rw [e, upd_same, if_pos (Or.inl rfl)]
        have hP : jP ∉ iN :: P := fun h => hjP_ri (hAi.mem_iff.2 (List.mem_cons_of_mem i h))
        rw [← map_swap_head hndi hP]
        exact (hAi.map _).symm
      · rw [upd_other _ _ _ _ e]
        by_cases e2 : r = rj
        · rw [e2, upd_same, if_pos (Or.inr rfl)]
          have hQ : i ∉ j :: Q := fun h => hi_rj (hAj.mem_iff.2 (List.mem_cons_of_mem jP h))
          rw [← map_swap_head2 hndj hQ]
          exact (hAj.map _).symm
        · rw [upd_other _ _ _ _ e2, upd_other _ _ _ _ e, if_neg (by simp [e, e2])]

end Exchange6

section Exchange7

variable {I : Instance} {s : Solution} {A : Nat → List Int}

/-- The cache of an endpoint of a move holds the neighbours and the removal costs that the
route getters give. -/
theorem cache_of_fields (hR : Rep I s A) (hdep : ∀ r, A r ≠ [] → (0 : Int) ∈ A r) {v o : Int}
    (hvo : v ≠ o) (ho : o ≠ 0 → (s.customers_list o).route_ptr ≠ 0) :
    (OneOneExchange.cache_of s v o).v = v ∧
    (OneOneExchange.cache_of s v o).prev =
      s.get_prev_vertex (s.get_route_index_fallback v o) v ∧
    (OneOneExchange.cache_of s v o).next =
      s.get_next_vertex (s.get_route_index_fallback v o) v ∧
    (OneOneExchange.cache_of s v o).prevprev =
      s.get_prev_vertex (s.get_route_index_fallback v o)
        (s.get_prev_vertex (s.get_route_index_fallback v o) v) ∧
    (OneOneExchange.cache_of s v o).vrem =
      -s.get_cost_prev_vertex (s.get_route_index_fallback v o) v -
        s.get_cost_prev_vertex (s.get_route_index_fallback v o)
          (s.get_next_vertex (s.get_route_index_fallback v o) v) ∧
    (OneOneExchange.cache_of s v o).prevrem =
      -s.get_cost_prev_vertex (s.get_route_index_fallback v o)
          (s.get_prev_vertex (s.get_route_index_fallback v o) v) -
        s.get_cost_prev_vertex (s.get_route_index_fallback v o) v := by
  by_cases hv : v = 0
  · subst hv
    have o0 : o ≠ 0 := fun e => hvo e.symm
    have hoin : o ∈ A (s.customers_list o).route_ptr :=
      ((hR.routes _).mem_iff o o0).2 ⟨rfl, ho o0⟩
    have h0in := hdep _ (List.ne_nil_of_mem hoin)
    obtain ⟨T, hT⟩ := exists_rotated_cons h0in
    have hoT : o ∈ T := by
      rcases List.mem_cons.1 (hT.mem_iff.1 hoin) with e | e
      · exact absurd e o0
      · exact e
    obtain ⟨y, t, rfl⟩ := List.exists_cons_of_ne_nil (List.ne_nil_of_mem hoT)
    have hnd := (RouteRep_isRotated hT (hR.routes _)).nodup
    obtain ⟨a1, _, _, a4, _⟩ := (hR.routes _).adjacent hT
    have hy0 : y ≠ 0 := fun e => (List.nodup_cons.1 hnd).1 (by simp [e])
    have hl0 : lastFrom y t ≠ 0 := fun e =>
      (List.nodup_cons.1 hnd).1 (e ▸ lastFrom_mem y t)
    have hfirst : (s.routes_list (s.customers_list o).route_ptr).first_customer ≠ 0 := by
      have := a1
      simp only [Solution.get_next_vertex, if_true] at this
      rw [this]
      exact hy0
    have hlast : (s.routes_list (s.customers_list o).route_ptr).last_customer ≠ 0 := by
      have := a4
      simp only [Solution.get_prev_vertex, if_true] at this
      rw [this]
      exact hl0
    simp [OneOneExchange.cache_of, OneOneExchange.prepare_cache12_backup,
      Solution.get_route_index_fallback, Solution.get_route_index, Solution.get_prev_vertex,
      Solution.get_next_vertex, Solution.get_cost_prev_vertex, Solution.get_last_customer,
      Solution.get_first_customer, Solution.get_prev_customer_vertex,
      Solution.get_cost_prev_depot, Solution.get_cost_prev_customer, hfirst, hlast]
  · simp [OneOneExchange.cache_of, OneOneExchange.prepare_cache12,
      Solution.get_route_index_fallback, Solution.get_route_index, Solution.get_prev_vertex,
      Solution.get_next_vertex, Solution.get_cost_prev_vertex,
      Solution.get_prev_customer_vertex, Solution.get_next_customer_vertex,
      Solution.get_cost_prev_customer, hv]

/-- The delta computed from the caches is the one that `compute_cost` reads off the
solution, for the move and for its twin. -/
theorem cached_cost_eq (hsym : CostSym I) (hR : Rep I s A)
    (hdep : ∀ r, A r ≠ [] → (0 : Int) ∈ A r) {i j : Int} (hij : i ≠ j)
    (hi : i ≠ 0 → (s.customers_list i).route_ptr ≠ 0)
    (hj : j ≠ 0 → (s.customers_list j).route_ptr ≠ 0) :
    OneOneExchange.compute_cost_cached I (I.cost i j) (OneOneExchange.cache_of s i j)
      (OneOneExchange.cache_of s j i) = OneOneExchange.compute_cost I s i j ∧
    OneOneExchange.compute_cost_pair I (I.cost i j) (OneOneExchange.cache_of s i j)
      (OneOneExchange.cache_of s j i) =
      (OneOneExchange.compute_cost I s i j, OneOneExchange.compute_cost I s j i) := by
  obtain ⟨a1, a2, a3, a4, a5, a6⟩ := cache_of_fields hR hdep hij hj
  obtain ⟨b1, b2, b3, b4, b5, b6⟩ := cache_of_fields hR hdep (fun e => hij e.symm) hi
  have s1 := hsym.1 i j
  have s2 := hsym.1 (s.get_prev_vertex (s.get_route_index_fallback i j) i)
    (s.get_prev_vertex (s.get_route_index_fallback j i) j)
  unfold OneOneExchange.compute_cost_cached OneOneExchange.compute_cost_pair
    OneOneExchange.compute_cost
  simp only [a1, a2, a3, a4, a5, a6, b1, b2, b3, b4, b5, b6, Prod.mk.injEq]
  refine ⟨by ring, by ring, ?_⟩
  rw [← s1, ← s2]
  ring

end Exchange7

namespace MoveGenerators

theorem CostsOK.insert_cost {I : Instance} {mg : MoveGenerators} (h : mg.CostsOK I) (a b : Int) :
    (mg.insert_pair (I.cost a b) a b).CostsOK I := by
  obtain ⟨f1, f2, _, _⟩ := insert_pair_fields mg (I.cost a b) a b
  obtain ⟨hl, hc⟩ := h
  refine ⟨by rw [f1, f2]; simp; omega, fun m x y e => ?_⟩
  rw [f1, getElem?_two_append] at e
  rw [f2]
  by_cases c1 : 2 * m < mg.moves.length
  · rw [if_pos c1] at e
    rw [List.getElem?_append_left (by omega)]
    exact hc m x y e
  · rw [if_neg c1] at e
    by_cases c2 : 2 * m = mg.moves.length
    · rw [if_pos c2] at e
      have hm : m = mg.edge_costs.length := by omega
      have hxy : (a, b) = (x, y) := Option.some.inj e
      have hx : a = x := congrArg Prod.fst hxy
      have hy : b = y := congrArg Prod.snd hxy
      rw [hm, ← hx, ← hy]
      simp
    · rw [if_neg c2] at e
      by_cases c3 : 2 * m = mg.moves.length + 1
      · omega
      · rw [if_neg c3] at e
        exact absurd e (by simp)

theorem CostsOK.step_cost {I : Instance} (hsym : CostSym I) (nb : Int → List Int)
    {mg : MoveGenerators} (h : mg.CostsOK I) (i : Int) (p : Nat) :
    (pair_step I nb mg i p).CostsOK I := by
  have k1 := h.insert_cost i ((nb i).getD p 0)
  have k2 := h.insert_cost ((nb i).getD p 0) i
  rw [← hsym.1 i ((nb i).getD p 0)] at k2
  unfold MoveGenerators.pair_step
  simp only
  split_ifs
  · exact k1
  · exact k2
  · exact h
  · exact k2
  · exact h

theorem CostsOK.fold_cost {I : Instance} (hsym : CostSym I) (nb : Int → List Int) (i : Int) :
    ∀ (l : List Nat) (mg : MoveGenerators), mg.CostsOK I →
      (l.foldl (fun m p => pair_step I nb m i p) mg).CostsOK I := by
  intro l
  induction l with
  | nil => intro mg h; exact h
  | cons p l ih =>
    intro mg h
    rw [List.foldl_cons]
    exact ih _ (h.step_cost hsym nb i p)

theorem CostsOK.loops {I : Instance} (hsym : CostSym I) (nb : Int → List Int) :
    ∀ (l : List Nat) (mg : MoveGenerators), mg.CostsOK I →
      (l.foldl (fun (m : MoveGenerators) (i : Nat) => pair_loop I nb m (i : Int))
        mg).CostsOK I := by
  intro l
  induction l with
  | nil => intro mg h; exact h
  | cons p l ih =>
    intro mg h
    rw [List.foldl_cons]
    exact ih _ (CostsOK.fold_cost hsym nb _ _ mg h)

theorem create_costs {I : Instance} (hsym : CostSym I) (nb : Int → List Int) (k : Nat) :
    (create I nb k).CostsOK I := by
  have h : (pair_loops I nb (init I k)).CostsOK I :=
    CostsOK.loops hsym nb _ (init I k) ⟨rfl, fun m a b e => by simp [init] at e⟩
  obtain ⟨e1, e2, _⟩ := sort_loop_moves I (pair_loops I nb (init I k))
  unfold create CostsOK
  rw [e1, e2]
  exact h

/-- The edge cost that the registry built by the constructor stores for a move is the cost
of the arc between its two vertices; this is the value `moves.get_edge_cost(move)` that
`compute_cost_pair` reads. -/
theorem create_edge_cost {I : Instance} {nb : Int → List Int} {k : Nat}
    (hnb : NbOK I nb (min k (I.vertices_num - 1))) (hsym : CostSym I) (idx : Nat)
    (hidx : idx < (create I nb k).size) :
    (create I nb k).get_edge_cost idx =
      I.cost ((create I nb k).get idx).1 ((create I nb k).get idx).2 := by
  have hP := create_inv hnb hsym
  obtain ⟨hl, hc⟩ := create_costs hsym nb k
  generalize create I nb k = mg at *
  have hsz : mg.size = mg.moves.length := rfl
  obtain ⟨a, b, _, e1, e2⟩ := hP.shape (idx / 2) (by omega)
  have hcost := hc (idx / 2) a b e1
  unfold get_edge_cost
  rw [List.getD_eq_getElem?_getD, hcost]
  rcases Nat.mod_two_eq_zero_or_one idx with hpar | hpar
  · have e : 2 * (idx / 2) = idx := by omega
    rw [e] at e1
    rw [get_of_getElem? e1]
    rfl
  · have e : 2 * (idx / 2) + 1 = idx := by omega
    rw [e] at e2
    rw [get_of_getElem? e2]
    exact hsym.1 a b

end MoveGenerators
section Exchange7

variable {I : Instance} {s : Solution} {A : Nat → List Int}

/-- The lists left by an exchange of `a` and `b` that lie in the same route: each list is a
permutation of the list before. -/
theorem swap_perm_intra {a x b y : Int} {X Y l : List Int}
    (hl : l ~r (a :: x :: (X ++ b :: y :: Y))) (hnd : l.Nodup) :
    (l.map (fun v => if v = a then b else if v = b then a else v)).Perm l := by
  have hnd2 : (a :: x :: (X ++ b :: y :: Y)).Nodup := hl.perm.nodup_iff.1 hnd
  have h1 := (hl.map (fun v => if v = a then b else if v = b then a else v)).perm
  rw [map_swap_intra hnd2] at h1
  refine h1.trans (List.Perm.trans ?_ hl.perm.symm)
  have e1 : (b :: x :: (X ++ a :: y :: Y)).Perm (b :: a :: x :: (X ++ y :: Y)) := by
    refine List.Perm.cons b ?_
    have : (x :: (X ++ a :: y :: Y)) = (x :: X) ++ a :: (y :: Y) := by simp
    rw [this]
    exact List.perm_middle
  have e2 : (a :: x :: (X ++ b :: y :: Y)).Perm (a :: b :: x :: (X ++ y :: Y)) := by
    refine List.Perm.cons a ?_
    have : (x :: (X ++ b :: y :: Y)) = (x :: X) ++ b :: (y :: Y) := by simp
    rw [this]
    exact List.perm_middle
  exact e1.trans ((List.Perm.swap a b _).trans e2.symm)

/-- The list of the route that gives `a` and receives `b`. -/
theorem swap_perm_give {a b : Int} {t l : List Int} (hl : l ~r (a :: t)) (hnd : l.Nodup)
    (hb : b ∉ l) :
    (l.map (fun v => if v = a then b else if v = b then a else v)).Perm (b :: t) := by
  have hnd2 : (a :: t).Nodup := hl.perm.nodup_iff.1 hnd
  have h1 := (hl.map (fun v => if v = a then b else if v = b then a else v)).perm
  rw [map_swap_head hnd2 (fun h => hb (hl.perm.mem_iff.2 (List.mem_cons_of_mem a h)))] at h1
  exact h1

/-- The list of the route that gives `b` and receives `a`. -/
theorem swap_perm_take {a b : Int} {t l : List Int} (hl : l ~r (b :: t)) (hnd : l.Nodup)
    (ha : a ∉ l) :
    (l.map (fun v => if v = a then b else if v = b then a else v)).Perm (a :: t) := by
  have hnd2 : (b :: t).Nodup := hl.perm.nodup_iff.1 hnd
  have h1 := (hl.map (fun v => if v = a then b else if v = b then a else v)).perm
  rw [map_swap_head2 hnd2 (fun h => ha (hl.perm.mem_iff.2 (List.mem_cons_of_mem b h)))] at h1
  exact h1

end Exchange7
section Exchange8

variable {I : Instance} {s : Solution} {A : Nat → List Int}

/-- A feasible exchange on a consistent solution whose routes respect the capacity and
serve at least one customer each: the solution after `execute` has the same present
routes, serves the same vertices, every route respects the capacity and serves a
customer. -/
theorem execute_partition (hR : Rep I s A) (hC : CostOK I s A)
    (hdep : ∀ r, A r ≠ [] → (0 : Int) ∈ A r)
    (hcap : ∀ r, loadOf I (A r) ≤ I.vehicle_capacity)
    (hfull : ∀ r, A r ≠ [] → ∃ c ∈ A r, c ≠ 0) {i j : Int} (hij : i ≠ j)
    (hi : i ≠ 0 → (s.customers_list i).route_ptr ≠ 0)
    (hj : j ≠ 0 → (s.customers_list j).route_ptr ≠ 0)
    (hf : OneOneExchange.is_feasible I s i j = true) :
    ∃ B, Rep I (OneOneExchange.execute I s i j) B ∧
      CostOK I (OneOneExchange.execute I s i j) B ∧ (∀ r, B r ≠ [] → (0 : Int) ∈ B r) ∧
      (∀ v, (∃ r, v ∈ B r) ↔ ∃ r, v ∈ A r) ∧
      (∀ r, loadOf I (B r) ≤ I.vehicle_capacity) ∧
      (∀ r, B r ≠ [] → ∃ c ∈ B r, c ≠ 0) := by
  obtain ⟨B, h1, h2, h3, h4, -⟩ := execute_spec hR hC hdep hij hi hj hf
  refine ⟨B, h1, h2, h3, ?_⟩
  generalize hri : s.get_route_index_fallback i j = ri at h4
  generalize hrj : s.get_route_index_fallback j i = rj at h4
  generalize hp : s.get_prev_vertex rj j = p at h4
  have hother : ∀ r, ¬ (r = ri ∨ r = rj) → (B r).Perm (A r) := by
    intro r hr
    have := h4 r
    rw [if_neg hr] at this
    exact this.perm
  rcases exchange_shape hR hdep hij hi hj hf with ⟨hsame, X, Y, hsh⟩ | ⟨hne, hi0, hp0, P, Q, hP, hQ⟩
  · rw [hri, hrj] at hsame
    rw [hri, hrj, hp] at hsh
    have hall : ∀ r, (B r).Perm (A r) := by
      intro r
      by_cases hr : r = ri ∨ r = rj
      · have := h4 r
        rw [if_pos hr] at this
        have hr2 : r = ri := by rcases hr with e | e; exact e; exact e.trans hsame.symm
        subst hr2
        exact this.perm.trans (swap_perm_intra hsh (hR.routes r).nodup)
      · exact hother r hr
    refine ⟨fun v => ⟨fun ⟨r, h⟩ => ⟨r, (hall r).mem_iff.1 h⟩,
      fun ⟨r, h⟩ => ⟨r, (hall r).mem_iff.2 h⟩⟩, fun r => ?_, fun r hr => ?_⟩
    · rw [loadOf_perm I (hall r)]; exact hcap r
    · have hA : A r ≠ [] := fun e => hr ((List.perm_nil.1 (e ▸ hall r)))
      obtain ⟨c, hc, hc0⟩ := hfull r hA
      exact ⟨c, (hall r).mem_iff.2 hc, hc0⟩
  · rw [hri, hrj] at hne
    rw [hri] at hP
    rw [hrj, hp] at hQ hp0
    generalize hiN : s.get_next_vertex ri i = iN at hP
    have hiA : i ∈ A ri := hP.perm.mem_iff.2 (List.mem_cons_self _ _)
    have hpA : p ∈ A rj := hQ.perm.mem_iff.2 (List.mem_cons_self _ _)
    have hjA : j ∈ A rj := hQ.perm.mem_iff.2 (by simp)
    have hpi : p ∉ A ri := fun h =>
      hne ((hR.route_of_mem hp0 h).1.symm.trans (hR.route_of_mem hp0 hpA).1)
    have hij2 : i ∉ A rj := fun h =>
      hne ((hR.route_of_mem hi0 hiA).1.symm.trans (hR.route_of_mem hi0 h).1)
    have hBi : (B ri).Perm (p :: iN :: P) := by
      have := h4 ri
      rw [if_pos (Or.inl rfl)] at this
      exact this.perm.trans (swap_perm_give hP (hR.routes ri).nodup hpi)
    have hBj : (B rj).Perm (i :: j :: Q) := by
      have := h4 rj
      rw [if_pos (Or.inr rfl)] at this
      exact this.perm.trans (swap_perm_take hQ (hR.routes rj).nodup hij2)
    have hj0 : j ≠ 0 := by
      intro e
      have hrj2 : rj = (s.customers_list i).route_ptr := by
        rw [← hrj, e]; simp [Solution.get_route_index_fallback]
      have hri2 : ri = (s.customers_list i).route_ptr := by
        rw [← hri]; simp [Solution.get_route_index_fallback, hi0]
      exact hne (hri2.trans hrj2.symm)
    have hfe := hf
    simp only [OneOneExchange.is_feasible, hri, hrj, hp, Bool.or_eq_true, Bool.and_eq_true,
      decide_eq_true_eq] at hfe
    rcases hfe with ⟨⟨⟨-, -⟩, hl1⟩, hl2⟩ | ⟨⟨he, -⟩, -⟩
    swap
    · exact absurd he hne
    have hAi : A ri ≠ [] := List.ne_nil_of_mem hiA
    have hAj : A rj ≠ [] := List.ne_nil_of_mem hpA
    have eli : s.get_route_load ri = loadOf I (A ri) := (hR.routes ri).load hAi
    have elj : s.get_route_load rj = loadOf I (A rj) := (hR.routes rj).load hAj
    have eAi : loadOf I (A ri) = I.demand i + loadOf I (iN :: P) := by
      rw [loadOf_perm I hP.perm, loadOf_cons, if_neg hi0]
    have eAj : loadOf I (A rj) = I.demand p + loadOf I (j :: Q) := by
      rw [loadOf_perm I hQ.perm, loadOf_cons, if_neg hp0]
    refine ⟨fun v => ⟨?_, ?_⟩, fun r => ?_, fun r hr => ?_⟩
    · rintro ⟨r, h⟩
      by_cases e1 : r = ri
      · subst e1
        rcases List.mem_cons.1 (hBi.mem_iff.1 h) with e | e
        · exact ⟨rj, e ▸ hpA⟩
        · exact ⟨r, hP.perm.mem_iff.2 (List.mem_cons_of_mem _ e)⟩
      by_cases e2 : r = rj
      · subst e2
        rcases List.mem_cons.1 (hBj.mem_iff.1 h) with e | e
        · exact ⟨ri, e ▸ hiA⟩
        · exact ⟨r, hQ.perm.mem_iff.2 (List.mem_cons_of_mem _ e)⟩
      exact ⟨r, (hother r (by tauto)).mem_iff.1 h⟩
    · rintro ⟨r, h⟩
      by_cases e1 : r = ri
      · subst e1
        rcases List.mem_cons.1 (hP.perm.mem_iff.1 h) with e | e
        · exact ⟨rj, hBj.mem_iff.2 (e ▸ List.mem_cons_self _ _)⟩
        · exact ⟨r, hBi.mem_iff.2 (List.mem_cons_of_mem _ e)⟩
      by_cases e2 : r = rj
      · subst e2
        rcases List.mem_cons.1 (hQ.perm.mem_iff.1 h) with e | e
        · exact ⟨ri, hBi.mem_iff.2 (e ▸ List.mem_cons_self _ _)⟩
        · exact ⟨r, hBj.mem_iff.2 (List.mem_cons_of_mem _ e)⟩
      exact ⟨r, (hother r (by tauto)).mem_iff.2 h⟩
    · by_cases e1 : r = ri
      · subst e1
        rw [loadOf_perm I hBi, loadOf_cons, if_neg hp0]
        omega
      by_cases e2 : r = rj
      · subst e2
        rw [loadOf_perm I hBj, loadOf_cons, if_neg hi0]
        omega
      rw [loadOf_perm I (hother r (by tauto))]; exact hcap r
    · by_cases e1 : r = ri
      · subst e1
        exact ⟨p, hBi.mem_iff.2 (List.mem_cons_self _ _), hp0⟩
      by_cases e2 : r = rj
      · subst e2
        exact ⟨i, hBj.mem_iff.2 (List.mem_cons_self _ _), hi0⟩
      have hA : A r ≠ [] := fun e => hr ((List.perm_nil.1 (e ▸ hother r (by tauto))))
      obtain ⟨c, hc, hc0⟩ := hfull r hA
      exact ⟨c, (hother r (by tauto)).mem_iff.2 hc, hc0⟩

end Exchange8
theorem loadOf_nonneg {I : Instance} : ∀ (t : List Int), (∀ v ∈ t, v ≠ 0 → 0 < I.demand v) →
    0 ≤ loadOf I t
  | [], _ => by simp
  | x :: t, h => by
    rw [loadOf_cons]
    have := loadOf_nonneg t (fun v hv => h v (List.mem_cons_of_mem _ hv))
    by_cases e : x = 0
    · rw [if_pos e]; omega
    · rw [if_neg e]
      have := h x (List.mem_cons_self _ _) e
      omega

theorem loadOf_pos {I : Instance} : ∀ (t : List Int), (∀ v ∈ t, v ≠ 0 → 0 < I.demand v) →
    (∃ c ∈ t, c ≠ 0) → 0 < loadOf I t
  | [], _, ⟨c, hc, _⟩ => by cases hc
  | x :: t, h, ⟨c, hc, hc0⟩ => by
    rw [loadOf_cons]
    have hn := loadOf_nonneg t (fun v hv => h v (List.mem_cons_of_mem _ hv))
    by_cases e : x = 0
    · rw [if_pos e]
      rcases List.mem_cons.1 hc with g | g
      · exact absurd (g.trans e) hc0
      · have := loadOf_pos t (fun v hv => h v (List.mem_cons_of_mem _ hv)) ⟨c, g, hc0⟩
        omega
    · rw [if_neg e]
      have := h x (List.mem_cons_self _ _) e
      omega

theorem PoolFull.of_pool {s s2 : Solution} {A B : Nat → List Int} (h : PoolFull s A)
    (hp : s2.routes_pool = s.routes_pool) (hm : s2.max_number_routes = s.max_number_routes)
    (hAB : ∀ r, B r = [] → A r = []) : PoolFull s2 B := by
  intro r h0 h1 hB
  rw [hm] at h1
  rw [hp]
  exact h r h0 h1 (hAB r hB)

theorem PoolFull.push {s s2 : Solution} {A B : Nat → List Int} (h : PoolFull s A) (S : Nat)
    (hle : s.routes_pool.begin ≤ s.routes_pool.capacity)
    (hp : s2.routes_pool = s.routes_pool.push S)
    (hm : s2.max_number_routes = s.max_number_routes)
    (hAB : ∀ r, r ≠ S → B r = [] → A r = []) : PoolFull s2 B := by
  intro r h0 h1 hB
  rw [hm] at h1
  rw [hp]
  by_cases e : r = S
  · exact ⟨s.routes_pool.begin - 1, by simp [FixedSizeValueStack.push],
      by simp only [FixedSizeValueStack.push]; omega,
      by simp [FixedSizeValueStack.push, upd, e]⟩
  · obtain ⟨i, i1, i2, i3⟩ := h r h0 h1 (hAB r e hB)
    refine ⟨i, by simp only [FixedSizeValueStack.push]; omega, by simpa [FixedSizeValueStack.push] using i2, ?_⟩
    have : i ≠ s.routes_pool.begin - 1 := by omega
    simp [FixedSizeValueStack.push, upd, this, i3]

theorem PoolFull.take {I : Instance} {s s2 : Solution} {A B : Nat → List Int} (hR : Rep I s A)
    (h : PoolFull s A)
    (hb : s2.routes_pool.begin = s.routes_pool.begin + 1)
    (hc : s2.routes_pool.capacity = s.routes_pool.capacity)
    (ha : s2.routes_pool.array = s.routes_pool.array)
    (hm : s2.max_number_routes = s.max_number_routes)
    (hAB : ∀ r, B r = [] → A r = [] ∧ r ≠ s.routes_pool.array s.routes_pool.begin) :
    PoolFull s2 B := by
  intro r h0 h1 hB
  rw [hm] at h1
  obtain ⟨hA, hne⟩ := hAB r hB
  obtain ⟨i, i1, i2, i3⟩ := h r h0 h1 hA
  have : i ≠ s.routes_pool.begin := fun e => hne (by rw [← i3, e])
  exact ⟨i, by omega, by omega, by rw [ha]; exact i3⟩
/-- The route pool after `refresh_cumulative_loads` is the pool before. -/
theorem Solution.refresh_pool {I : Instance} {s : Solution} {A : Nat → List Int}
    (hR : Rep I s A) {r : Nat} (h0 : (0 : Int) ∈ A r) {c : Int} (hc : c ∈ A r) (hc0 : c ≠ 0)
    {fuel : Nat} (hf : I.vertices_num < fuel) {s2 : Solution}
    (e : Solution.refresh_cumulative_loads I s c fuel = some s2) :
    s2.routes_pool = s.routes_pool ∧ s2.max_number_routes = s.max_number_routes := by
  obtain ⟨t, ht⟩ := exists_rotated_cons h0
  have hct : c ∈ t := by
    have := ht.mem_iff.1 hc
    simp only [List.mem_cons] at this
    exact this.resolve_left hc0
  have hptr : (s.customers_list c).route_ptr = r := (hR.route_of_mem hc0 hc).1
  have htn : t ≠ [] := List.ne_nil_of_mem hct
  unfold Solution.refresh_cumulative_loads at e
  simp only [hptr] at e
  by_cases hflag : (s.routes_list r).needs_cumulative_load_update = true
  · rw [if_pos hflag] at e
    obtain ⟨s1, e1, _, _, _, _, f5, f6⟩ := Solution.update_cumulative_spec hR ht htn hf
    rw [e1] at e
    simp only [Option.map_some', Option.some.injEq] at e
    rw [← e]
    exact ⟨f5, f6⟩
  · rw [if_neg hflag] at e
    simp only [Option.some.injEq] at e
    rw [← e]
    exact ⟨rfl, rfl⟩

/-- Every state reached by the mutators keeps all absent routes in the pool, and the
number of route slots is the number of vertices plus one. -/
theorem Mutated.pool_full {I : Instance} (hsym : CostSym I) {fuel : Nat}
    (hf : I.vertices_num < fuel) {s : Solution} {A : Nat → List Int} (h : Mutated I fuel s A) :
    PoolFull s A ∧ s.max_number_routes = I.vertices_num + 1 := by
  induction h with
  | fresh h =>
    obtain ⟨_, f2, f3, f4, f5, _⟩ := Solution.fresh_fields I h
    refine ⟨fun r r0 r1 _ => ?_, f2⟩
    rw [f2] at r1
    refine ⟨(r : Int) - 1, by rw [f3]; omega, by rw [f4]; omega, ?_⟩
    rw [f5 _ (by omega) (by omega)]
    omega
  | @rotate s A r l hm hl ih =>
    refine ⟨ih.1.of_pool rfl rfl (fun q hq => ?_), ih.2⟩
    by_cases e : q = r
    · subst e
      rw [upd_same] at hq
      rw [hq] at hl
      exact List.isRotated_nil_iff.1 hl
    · rwa [upd_other _ _ _ _ e] at hq
  | @build s A ra c hm h1 h2 h3 h4 ih =>
    have hR := (Mutated.inv hsym hf hm).1
    obtain ⟨_, g2, g3, g4, g5, _⟩ := Solution.build_scalars I s ra c
    refine ⟨PoolFull.take hR ih.1 g3 g4 g5 g2 (fun q hq => ?_), g2.trans ih.2⟩
    rw [Solution.build_route_eq] at hq
    by_cases e : q = s.routes_pool.array s.routes_pool.begin
    · rw [e, upd_same] at hq
      exact absurd hq (by simp)
    · rw [upd_other _ _ _ _ e] at hq
      exact ⟨hq, e⟩
  | @remove s A ra r v t hm hA ht ih =>
    obtain ⟨p1, p2, _⟩ := Solution.remove_vertex_pool I s ra r v
    refine ⟨ih.1.of_pool p1 p2 (fun q hq => ?_), p2.trans ih.2⟩
    by_cases e : q = r
    · rw [e, upd_same] at hq
      exact absurd hq ht
    · rwa [upd_other _ _ _ _ e] at hq
  | @insert s A ra r w v t hm hA hv hv1 h1 h2 ih =>
    obtain ⟨p1, p2, _⟩ := Solution.insert_vertex_pool I s ra r w v
    refine ⟨ih.1.of_pool p1 p2 (fun q hq => ?_), p2.trans ih.2⟩
    by_cases e : q = r
    · rw [e, upd_same] at hq
      exact absurd hq (by simp)
    · rwa [upd_other _ _ _ _ e] at hq
  | @remove_route s A ra r hm hA ih =>
    have hR := (Mutated.inv hsym hf hm).1
    obtain ⟨_, g2, g3, _⟩ := Solution.remove_route_scalars s ra r
    refine ⟨ih.1.push r hR.pool_le g3 g2 (fun q e hq => ?_), g2.trans ih.2⟩
    rwa [upd_other _ _ _ _ e] at hq
  | @reverse s s2 A ra r a b xs ys hm hA hx hb e ih =>
    have hR := (Mutated.inv hsym hf hm).1
    have hlen : xs.length < fuel := by
      have h1 := hR.length_le r
      rw [hA] at h1
      simp only [List.length_cons, List.length_append] at h1
      omega
    obtain ⟨s4, e4, _, _, _, _, p1, p2⟩ := reverse_ok ra hsym hR (by rw [hA]) hx hb hlen
    have : s4 = s2 := Option.some.inj (e4.symm.trans e)
    rw [this] at p1 p2
    refine ⟨ih.1.of_pool p1 p2 (fun q hq => ?_), p2.trans ih.2⟩
    by_cases e : q = r
    · rw [e, upd_same] at hq
      simp at hq
    · rwa [upd_other _ _ _ _ e] at hq
  | @append s s2 A R S LR LS hm hRS hAR hAS hLR hLS e ih =>
    have hR := (Mutated.inv hsym hf hm).1
    have hlen : LS.length < fuel := by
      have h1 := hR.length_le S
      rw [hAS] at h1
      simp only [List.length_cons] at h1
      omega
    obtain ⟨s9, e9, _, _, _, _, _, hpool, hmax, _⟩ :=
      append_route_fields hR hRS hAR hAS hLS hlen
    have : s9 = s2 := Option.some.inj (e9.symm.trans e)
    rw [this] at hpool hmax
    refine ⟨ih.1.push S hR.pool_le hpool hmax (fun q e hq => ?_), hmax.trans ih.2⟩
    by_cases e2 : q = R
    · rw [e2, upd_same] at hq
      simp at hq
    · rwa [upd_other _ _ _ _ e2, upd_other _ _ _ _ e] at hq
  | @flag s A r hm ih => exact ⟨ih.1.of_pool rfl rfl (fun q hq => hq), ih.2⟩
  | @load_before s s2 A r c x hm h0 hc hc0 e ih =>
    have hR := (Mutated.inv hsym hf hm).1
    unfold Solution.get_route_load_before_included at e
    cases e3 : Solution.refresh_cumulative_loads I s c fuel with
    | none => rw [e3] at e; simp at e
    | some s3 =>
      rw [e3] at e
      simp only [Option.map_some', Option.some.injEq, Prod.mk.injEq] at e
      obtain ⟨p1, p2⟩ := Solution.refresh_pool hR h0 hc hc0 hf e3
      rw [e.2] at p1 p2
      exact ⟨ih.1.of_pool p1 p2 (fun q hq => hq), p2.trans ih.2⟩
  | @load_after s s2 A r c x hm h0 hc hc0 e ih =>
    have hR := (Mutated.inv hsym hf hm).1
    unfold Solution.get_route_load_after_included at e
    cases e3 : Solution.refresh_cumulative_loads I s c fuel with
    | none => rw [e3] at e; simp at e
    | some s3 =>
      rw [e3] at e
      simp only [Option.map_some', Option.some.injEq, Prod.mk.injEq] at e
      obtain ⟨p1, p2⟩ := Solution.refresh_pool hR h0 hc hc0 hf e3
      rw [e.2] at p1 p2
      exact ⟨ih.1.of_pool p1 p2 (fun q hq => hq), p2.trans ih.2⟩
/-- When every present route serves a customer and some customer is unserved, the pool is
not empty: the present routes are fewer than the route indices. -/
theorem Rep.pool_nonempty {I : Instance} {s : Solution} {A : Nat → List Int} (hR : Rep I s A)
    (hP : PoolFull s A) (hmax : s.max_number_routes = I.vertices_num + 1)
    (hfull : ∀ r, A r ≠ [] → ∃ c ∈ A r, c ≠ 0) {c : Int} (hc0 : 0 < c)
    (hcN : c < (I.vertices_num : Int)) (hun : ∀ r, c ∉ A r) :
    s.routes_pool.begin < s.routes_pool.capacity := by
  by_contra hneg
  have hb : s.routes_pool.capacity ≤ s.routes_pool.begin := not_lt.1 hneg
  have hall : ∀ r, 0 < r → r < I.vertices_num + 1 → A r ≠ [] := by
    intro r r0 r1 hA
    obtain ⟨i, i1, i2, _⟩ := hP r r0 (by rw [hmax]; exact r1) hA
    omega
  have hex : ∀ r, ∃ v : Int, 0 < r → r < I.vertices_num + 1 → v ∈ A r ∧ v ≠ 0 := by
    intro r
    by_cases h : 0 < r ∧ r < I.vertices_num + 1
    · obtain ⟨v, hv, hv0⟩ := hfull r (hall r h.1 h.2)
      exact ⟨v, fun _ _ => ⟨hv, hv0⟩⟩
    · exact ⟨0, fun a b => absurd ⟨a, b⟩ h⟩
  choose f hf using hex
  have hmaps : ∀ r ∈ (Finset.range (I.vertices_num + 1)).erase 0,
      (f r).toNat ∈ ((Finset.range I.vertices_num).erase 0).erase c.toNat := by
    intro r hr
    obtain ⟨r0, r1⟩ := Finset.mem_erase.1 hr
    obtain ⟨hv, hv0⟩ := hf r (Nat.pos_of_ne_zero r0) (Finset.mem_range.1 r1)
    obtain ⟨g1, g2⟩ := (hR.routes r).range _ hv
    refine Finset.mem_erase.2 ⟨fun e => ?_, Finset.mem_erase.2 ⟨by omega, Finset.mem_range.2 (by omega)⟩⟩
    have : f r = c := by omega
    exact hun r (this ▸ hv)
  have hinj : Set.InjOn (fun r : Nat => (f r).toNat)
      ((Finset.range (I.vertices_num + 1)).erase 0) := by
    intro a ha b hb2 e
    obtain ⟨a0, a1⟩ := Finset.mem_erase.1 (Finset.mem_coe.1 ha)
    obtain ⟨b0, b1⟩ := Finset.mem_erase.1 (Finset.mem_coe.1 hb2)
    obtain ⟨hva, hva0⟩ := hf a (Nat.pos_of_ne_zero a0) (Finset.mem_range.1 a1)
    obtain ⟨hvb, hvb0⟩ := hf b (Nat.pos_of_ne_zero b0) (Finset.mem_range.1 b1)
    have ga := ((hR.routes a).range _ hva).1
    have gb := ((hR.routes b).range _ hvb).1
    have e2 : f a = f b := by
      have e3 : (f a).toNat = (f b).toNat := e
      omega
    rw [e2] at hva
    exact (hR.route_of_mem hvb0 hva).1.symm.trans (hR.route_of_mem hvb0 hvb).1
  have hcard := Finset.card_le_card_of_injOn _ hmaps hinj
  have h0 : (0 : Nat) ∈ Finset.range (I.vertices_num + 1) := Finset.mem_range.2 (by omega)
  have h0b : (0 : Nat) ∈ Finset.range I.vertices_num := Finset.mem_range.2 (by omega)
  have hcm : c.toNat ∈ (Finset.range I.vertices_num).erase 0 :=
    Finset.mem_erase.2 ⟨by omega, Finset.mem_range.2 (by omega)⟩
  rw [Finset.card_erase_of_mem hcm, Finset.card_erase_of_mem h0, Finset.card_erase_of_mem h0b,
    Finset.card_range, Finset.card_range] at hcard
  omega
namespace Solution

theorem reset_lists_fields (I : Instance) (s : Solution) :
    (reset_lists I s).solution_cost = 0 ∧
    (reset_lists I s).max_number_routes = s.max_number_routes ∧
    (reset_lists I s).routes_pool = s.routes_pool.reset ∧
    (reset_lists I s).cache = s.cache ∧
    (∀ r, r < s.max_number_routes → ((reset_lists I s).routes_list r).in_solution = false) ∧
    (∀ r, s.max_number_routes ≤ r →
      ((reset_lists I s).routes_list r).in_solution = (s.routes_list r).in_solution) ∧
    (∀ v, 0 ≤ v → v < (I.vertices_num : Int) →
      ((reset_lists I s).customers_list v).route_ptr = 0 ∧
      ((reset_lists I s).customers_list v).next = -1 ∧
      ((reset_lists I s).customers_list v).prev = -1) ∧
    (∀ v, ¬ (0 ≤ v ∧ v < (I.vertices_num : Int)) →
      ((reset_lists I s).customers_list v).route_ptr = (s.customers_list v).route_ptr) := by
  unfold reset_lists
  obtain ⟨a1, a2, a3, a4, a5, a6⟩ := reset_vertices_fields
    (s.reset_scalars.reset_routes s.reset_scalars.max_number_routes) I.vertices_num
  obtain ⟨b1, b2, b3, b4, b5, b6⟩ := reset_routes_fields s.reset_scalars
    s.reset_scalars.max_number_routes
  refine ⟨by rw [a2, b2]; rfl, by rw [a3, b3]; rfl, by rw [a4, b4]; rfl, by rw [a5, b5]; rfl,
    fun r hr => ?_, fun r hr => ?_, fun v h0 h1 => ?_, fun v hv => ?_⟩
  · rw [a1, reset_routes_in_solution]
    have : r < s.reset_scalars.max_number_routes := hr
    rw [if_pos this]
  · rw [a1, reset_routes_in_solution]
    have : ¬ r < s.reset_scalars.max_number_routes := not_lt.2 hr
    rw [if_neg this]
    rfl
  · obtain ⟨i1, i2, i3⟩ := reset_vertices_customer
      (s.reset_scalars.reset_routes s.reset_scalars.max_number_routes) I.vertices_num v
    rw [i1, i2, i3]
    simp [h0, h1]
  · obtain ⟨i1, i2, i3⟩ := reset_vertices_customer
      (s.reset_scalars.reset_routes s.reset_scalars.max_number_routes) I.vertices_num v
    rw [i3, if_neg hv, b1]
    rfl

end Solution

/-- Method `reset` on any consistent solution: it returns, given fuel for the entries of
the cache, and leaves the empty solution, with the pool holding `1 .. vertices_num` in
this order. -/
theorem reset_rep {I : Instance} {s : Solution} {A : Nat → List Int} (hR : Rep I s A)
    (hmax : s.max_number_routes = I.vertices_num + 1) {l : List Int} (hc : s.cache.Holds l)
    {fuel : Nat} (hf : l.length < fuel) :
    ∃ s0, Solution.reset I s fuel = some s0 ∧ Rep I s0 (fun _ => []) ∧
      CostOK I s0 (fun _ => []) ∧ s0.max_number_routes = I.vertices_num + 1 ∧
      s0.routes_pool.begin = 0 ∧ s0.routes_pool.capacity = (I.vertices_num : Int) ∧
      (∀ i, 0 ≤ i → i < (I.vertices_num : Int) → s0.routes_pool.array i = (i + 1).toNat) ∧
      s0.solution_cost = 0 := by
  obtain ⟨f1, f2, f3, f4, f5, f6, f7, f8⟩ := Solution.reset_lists_fields I s
  obtain ⟨c1, e1, _, _⟩ := LRUCache.clear_holds s.cache l fuel hc hf
  have hcap : s.routes_pool.capacity = (I.vertices_num : Int) := by
    rw [hR.pool_cap, hmax]; push_cast; ring
  have hin : ∀ r, ((Solution.reset_lists I s).routes_list r).in_solution = false := by
    intro r
    by_cases hr : r < s.max_number_routes
    · exact f5 r hr
    · rw [f6 r (not_lt.1 hr)]
      by_contra hne
      have h1 : (s.routes_list r).in_solution = true := by simpa using hne
      exact hr (hR.bound r ((hR.routes r).present_iff.2 h1)).2
  have hptr : ∀ v, v ≠ 0 → ((Solution.reset_lists I s).customers_list v).route_ptr = 0 := by
    intro v hv
    by_cases hr : 0 ≤ v ∧ v < (I.vertices_num : Int)
    · exact (f7 v hr.1 hr.2).1
    · rw [f8 v hr]
      by_contra hne
      have := ((hR.routes (s.customers_list v).route_ptr).mem_iff v hv).2 ⟨rfl, hne⟩
      exact hr ((hR.routes _).range v this)
  refine ⟨(Solution.reset_lists I s).reset_finish c1, ?_, ?_, ?_, f2.trans hmax, ?_, ?_, ?_, f1⟩
  · unfold Solution.reset
    rw [f4, e1]
  · refine ⟨fun r => ⟨?_, ?_, ?_, ?_, ?_, ?_, ?_, ?_⟩, ?_, ?_, ?_, ?_, ?_, ?_, ?_⟩
    · have := hin r
      simp only [Solution.reset_finish]
      simp [this]
    · intro h; exact absurd rfl h
    · exact List.nodup_nil
    · intro v hv; exact absurd hv (List.not_mem_nil v)
    · intro v hv
      simp only [List.not_mem_nil, false_iff, not_and, not_not]
      intro e
      have := hptr v hv
      simp only [Solution.reset_finish] at e
      rw [this] at e
      exact e.symm
    · intro h; exact absurd rfl h
    · intro h; exact absurd rfl h
    · intro h; exact absurd rfl h
    · intro r h; exact absurd rfl h
    · intro v h1 h2 _
      exact (f7 v (le_of_lt h1) h2).2
    · show (Solution.reset_lists I s).routes_pool.begin ≤ (Solution.reset_lists I s).routes_pool.capacity
      rw [f3]
      simp only [FixedSizeValueStack.reset]
      rw [hcap]; exact Int.natCast_nonneg _
    · intro i h1 h2
      have h1b : (Solution.reset_lists I s).routes_pool.begin ≤ i := h1
      have h2b : i < (Solution.reset_lists I s).routes_pool.capacity := h2
      rw [f3] at h1b h2b
      simp only [FixedSizeValueStack.reset] at h1b h2b
      show _ ∧ 0 < (Solution.reset_lists I s).routes_pool.array i ∧
        (Solution.reset_lists I s).routes_pool.array i < (Solution.reset_lists I s).max_number_routes
      rw [f3, f2, hmax]
      simp only [FixedSizeValueStack.reset, if_pos (And.intro h1b h2b)]
      refine ⟨trivial, ?_, ?_⟩ <;> omega
    · intro i j h1 h2 h3 h4 e
      have h1b : (Solution.reset_lists I s).routes_pool.begin ≤ i := h1
      have h2b : i < (Solution.reset_lists I s).routes_pool.capacity := h2
      have h3b : (Solution.reset_lists I s).routes_pool.begin ≤ j := h3
      have h4b : j < (Solution.reset_lists I s).routes_pool.capacity := h4
      have eb : (Solution.reset_lists I s).routes_pool.array i =
        (Solution.reset_lists I s).routes_pool.array j := e
      rw [f3] at h1b h2b h3b h4b eb
      simp only [FixedSizeValueStack.reset] at h1b h2b h3b h4b eb
      rw [if_pos (And.intro h1b h2b), if_pos (And.intro h3b h4b)] at eb
      omega
    · show 0 ≤ (Solution.reset_lists I s).routes_pool.begin
      rw [f3]
      simp [FixedSizeValueStack.reset]
    · show (Solution.reset_lists I s).routes_pool.capacity =
        ((Solution.reset_lists I s).max_number_routes : Int) - 1
      rw [f3, f2]
      simp only [FixedSizeValueStack.reset]
      exact hR.pool_cap
  · unfold CostOK
    show (Solution.reset_lists I s).solution_cost = _
    rw [f1]
    simp [cycCost]
  · show (Solution.reset_lists I s).routes_pool.begin = 0
    rw [f3]; rfl
  · show (Solution.reset_lists I s).routes_pool.capacity = _
    rw [f3]; exact hcap
  · intro i h1 h2
    show (Solution.reset_lists I s).routes_pool.array i = _
    rw [f3]
    simp only [FixedSizeValueStack.reset]
    rw [if_pos (And.intro h1 (hcap ▸ h2))]
namespace Savings

theorem singles_succ (n : Nat) :
    upd (singles n) (n + 1) [0, ((n : Int) + 1)] = singles (n + 1) := by
  funext r
  unfold upd singles
  by_cases e : r = n + 1
  · subst e
    simp
  · rw [if_neg e]
    by_cases h : 0 < r ∧ r ≤ n
    · rw [if_pos h, if_pos ⟨h.1, by omega⟩]
    · rw [if_neg h, if_neg (fun h2 => h ⟨h2.1, by omega⟩)]

theorem singles_mem {n r : Nat} {v : Int} (h : v ∈ singles n r) :
    0 < r ∧ r ≤ n ∧ (v = 0 ∨ v = (r : Int)) := by
  unfold singles at h
  by_cases c : 0 < r ∧ r ≤ n
  · rw [if_pos c] at h
    simp only [List.mem_cons, List.mem_singleton, List.not_mem_nil, or_false] at h
    exact ⟨c.1, c.2, h⟩
  · rw [if_neg c] at h
    cases h

/-- The state after the routes of the customers `1 .. n` have been built from the empty
solution: customer `c` is alone in route `c`. -/
theorem build_all_spec {I : Instance} (hsym : CostSym I) {s0 : Solution}
    (h0 : Rep I s0 (fun _ => [])) (hC0 : CostOK I s0 (fun _ => []))
    (hmax : s0.max_number_routes = I.vertices_num + 1) (hb : s0.routes_pool.begin = 0)
    (hcap : s0.routes_pool.capacity = (I.vertices_num : Int))
    (harr : ∀ i, 0 ≤ i → i < (I.vertices_num : Int) → s0.routes_pool.array i = (i + 1).toNat)
    (hcost : s0.solution_cost = 0) (n : Nat) (hn : n + 1 ≤ I.vertices_num) :
    Rep I (build_all I s0 n) (singles n) ∧ CostOK I (build_all I s0 n) (singles n) ∧
    (build_all I s0 n).routes_pool.begin = (n : Int) ∧
    (build_all I s0 n).routes_pool.capacity = (I.vertices_num : Int) ∧
    (build_all I s0 n).routes_pool.array = s0.routes_pool.array ∧
    (build_all I s0 n).solution_cost = singles_cost I n ∧
    (build_all I s0 n).max_number_routes = I.vertices_num + 1 := by
  induction n with
  | zero =>
    have e : singles 0 = fun _ => [] := by
      funext r
      unfold singles
      rw [if_neg (by omega)]
    rw [e]
    exact ⟨h0, hC0, by simpa using hb, hcap, rfl, hcost, hmax⟩
  | succ n ih =>
    obtain ⟨i1, i2, i3, i4, i5, i6, i7⟩ := ih (by omega)
    have hpool : (build_all I s0 n).routes_pool.begin < (build_all I s0 n).routes_pool.capacity := by
      rw [i3, i4]; omega
    have hc : (0 : Int) < (n : Int) + 1 ∧ (n : Int) + 1 < (I.vertices_num : Int) := by
      constructor <;> omega
    have hptr : ((build_all I s0 n).customers_list ((n : Int) + 1)).route_ptr = 0 := by
      refine i1.absent_ptr (by omega) (fun r h => ?_)
      obtain ⟨_, g2, g3⟩ := singles_mem h
      omega
    have hroute : (Solution.build_one_customer_route I (build_all I s0 n) false ((n : Int) + 1)).1
        = n + 1 := by
      rw [Solution.build_route_eq, i3, i5, harr _ (by omega) (by omega)]
      omega
    have r1 := build_rep false hsym i1 hc hptr hpool
    have r2 := build_costOK false (c := (n : Int) + 1) hsym i1 i2 hpool
    rw [hroute, singles_succ] at r1 r2
    obtain ⟨g1, g2, g3, g4, g5, _⟩ :=
      Solution.build_scalars I (build_all I s0 n) false ((n : Int) + 1)
    refine ⟨r1, r2, ?_, ?_, ?_, ?_, ?_⟩
    · show (Solution.build_one_customer_route I (build_all I s0 n) false ((n : Int) + 1)).2.routes_pool.begin = _
      rw [g3, i3]; push_cast; ring
    · show (Solution.build_one_customer_route I (build_all I s0 n) false ((n : Int) + 1)).2.routes_pool.capacity = _
      rw [g4, i4]
    · show (Solution.build_one_customer_route I (build_all I s0 n) false ((n : Int) + 1)).2.routes_pool.array = _
      rw [g5, i5]
    · show (Solution.build_one_customer_route I (build_all I s0 n) false ((n : Int) + 1)).2.solution_cost = _
      rw [g1, i6]; rfl
    · show (Solution.build_one_customer_route I (build_all I s0 n) false ((n : Int) + 1)).2.max_number_routes = _
      rw [g2, i7]

end Savings
namespace Savings

variable {I : Instance} {s : Solution} {A : Nat → List Int}

/-- One call `append_route(R, S)` of the merging loop, for two distinct present routes whose
loads fit together in a vehicle. -/
theorem Merged.append_merge (h : Merged I s A) {R S : Nat} (hRS : R ≠ S) (hR : A R ≠ [])
    (hS : A S ≠ [])
    (hload : s.get_route_load R + s.get_route_load S ≤ I.vehicle_capacity) {fuel : Nat}
    (hf : I.vertices_num ≤ fuel) :
    ∃ s9 B, s.append_route I R S fuel = some s9 ∧ Merged I s9 B ∧
      ((∀ a b : Int, 0 < a → a < (I.vertices_num : Int) → 0 < b → b < (I.vertices_num : Int) →
        I.cost a b ≤ I.cost a 0 + I.cost 0 b) → s9.solution_cost ≤ s.solution_cost) := by
  obtain ⟨LR, hAR, hLR⟩ := h.shape R hR
  obtain ⟨LS, hAS, hLS⟩ := h.shape S hS
  have hlen : LS.length < fuel := by
    have h1 := h.rep.length_le S
    rw [hAS] at h1
    simp only [List.length_cons] at h1
    omega
  obtain ⟨s9, e9, h1, h2, h3⟩ := append_route_rep h.rep hRS hAR hAS hLR hLS hlen
  have h4 := append_route_costOK h.rep h.cost hRS hAR hAS h2 h3
  refine ⟨s9, _, e9, ⟨h1, h4, fun r hr => ?_, fun c c0 c1 => ?_, fun r hr => ?_⟩, fun htri => ?_⟩
  · by_cases e1 : r = R
    · rw [e1, upd_same]
      exact ⟨LR ++ LS, rfl, by simp [hLR]⟩
    · rw [upd_other _ _ _ _ e1] at hr ⊢
      by_cases e2 : r = S
      · rw [e2, upd_same] at hr
        exact absurd rfl hr
      · rw [upd_other _ _ _ _ e2] at hr ⊢
        exact h.shape r hr
  · obtain ⟨r, hr⟩ := h.served c c0 c1
    by_cases e1 : r = R
    · refine ⟨R, ?_⟩
      rw [upd_same]
      rw [e1, hAR] at hr
      rcases List.mem_cons.1 hr with e | e
      · omega
      · exact List.mem_cons_of_mem _ (List.mem_append_left _ e)
    · by_cases e2 : r = S
      · refine ⟨R, ?_⟩
        rw [upd_same]
        rw [e2, hAS] at hr
        rcases List.mem_cons.1 hr with e | e
        · omega
        · exact List.mem_cons_of_mem _ (List.mem_append_right _ e)
      · exact ⟨r, by rw [upd_other _ _ _ _ e1, upd_other _ _ _ _ e2]; exact hr⟩
  · by_cases e1 : r = R
    · rw [e1, upd_same]
      have l1 : s.get_route_load R = loadOf I (A R) := (h.rep.routes R).load hR
      have l2 : s.get_route_load S = loadOf I (A S) := (h.rep.routes S).load hS
      rw [hAR] at l1
      rw [hAS] at l2
      rw [loadOf_cons, if_pos rfl] at l1 l2 ⊢
      rw [loadOf_append]
      omega
    · rw [upd_other _ _ _ _ e1] at hr ⊢
      by_cases e2 : r = S
      · rw [e2, upd_same] at hr
        exact absurd rfl hr
      · rw [upd_other _ _ _ _ e2] at hr ⊢
        exact h.cap r hr
  · rw [h2]
    obtain ⟨x, t2, rfl⟩ : ∃ x t2, LS = x :: t2 := by
      cases LS with
      | nil => exact absurd rfl hLS
      | cons x t2 => exact ⟨x, t2, rfl⟩
    rw [append_cost_eq]
    obtain ⟨y, t1, rfl⟩ : ∃ y t1, LR = y :: t1 := by
      cases LR with
      | nil => exact absurd rfl hLR
      | cons y t1 => exact ⟨y, t1, rfl⟩
    have hlast : lastFrom 0 (y :: t1) ∈ y :: t1 := by
      rw [lastFrom_cons]
      exact lastFrom_mem y t1
    have ndR := (h.rep.routes R).nodup
    have ndS := (h.rep.routes S).nodup
    rw [hAR] at ndR
    rw [hAS] at ndS
    have g1 := (h.rep.routes R).range (lastFrom 0 (y :: t1)) (by rw [hAR]; exact List.mem_cons_of_mem _ hlast)
    have g2 := (h.rep.routes S).range x (by rw [hAS]; simp)
    have n1 : lastFrom 0 (y :: t1) ≠ 0 := fun e => (List.nodup_cons.1 ndR).1 (e ▸ hlast)
    have n2 : x ≠ 0 := fun e => (List.nodup_cons.1 ndS).1 (by rw [← e]; simp)
    have := htri (lastFrom 0 (y :: t1)) x (by omega) g1.2 (by omega) g2.2
    omega

/-- A customer of a solution that serves every customer lies in the route its
`route_ptr` names, which is present. -/
theorem Merged.route_present (h : Merged I s A) {c : Int} (c0 : 0 < c)
    (c1 : c < (I.vertices_num : Int)) : A (s.get_route_index c) ≠ [] := by
  obtain ⟨r, hr⟩ := h.served c c0 c1
  have := (h.rep.route_of_mem (ne_of_gt c0) hr).1
  unfold Solution.get_route_index
  rw [this]
  exact List.ne_nil_of_mem hr

/-- One iteration of the merging loop keeps the invariant and, when the costs satisfy the
triangle inequality through the depot, does not increase the cost. -/
theorem Merged.merge_step_inv (h : Merged I s A) (sv : Saving) (hi : 0 < sv.i ∧ sv.i < (I.vertices_num : Int))
    (hj : 0 < sv.j ∧ sv.j < (I.vertices_num : Int)) {fuel : Nat} (hf : I.vertices_num ≤ fuel) :
    ∃ s1 B, merge_step I fuel s sv = some s1 ∧ Merged I s1 B ∧
      ((∀ a b : Int, 0 < a → a < (I.vertices_num : Int) → 0 < b → b < (I.vertices_num : Int) →
        I.cost a b ≤ I.cost a 0 + I.cost 0 b) → s1.solution_cost ≤ s.solution_cost) := by
  have hRi := h.route_present hi.1 hi.2
  have hRj := h.route_present hj.1 hj.2
  unfold merge_step
  simp only
  by_cases e : s.get_route_index sv.i = s.get_route_index sv.j
  · rw [if_pos e]
    exact ⟨s, A, rfl, h, fun _ => le_refl _⟩
  · rw [if_neg e]
    by_cases c1 : s.get_last_customer (s.get_route_index sv.i) = sv.i ∧
        s.get_first_customer (s.get_route_index sv.j) = sv.j ∧
        s.get_route_load (s.get_route_index sv.i) + s.get_route_load (s.get_route_index sv.j) ≤
          I.vehicle_capacity
    · rw [if_pos c1]
      exact h.append_merge e hRi hRj c1.2.2 hf
    · rw [if_neg c1]
      by_cases c2 : s.get_last_customer (s.get_route_index sv.j) = sv.j ∧
          s.get_first_customer (s.get_route_index sv.i) = sv.i ∧
          s.get_route_load (s.get_route_index sv.i) + s.get_route_load (s.get_route_index sv.j) ≤
            I.vehicle_capacity
      · rw [if_pos c2]
        exact h.append_merge (fun e2 => e e2.symm) hRj hRi (by have := c2.2.2; omega) hf
      · rw [if_neg c2]
        exact ⟨s, A, rfl, h, fun _ => le_refl _⟩

/-- The merging loop, run on any list of savings between customers, returns and keeps the
invariant; with the triangle inequality through the depot it does not increase the cost. -/
theorem Merged.merge_loop_inv {fuel : Nat} (hf : I.vertices_num ≤ fuel) : ∀ (l : List Saving)
    (s : Solution) (A : Nat → List Int), Merged I s A →
    (∀ sv ∈ l, (0 < sv.i ∧ sv.i < (I.vertices_num : Int)) ∧
      (0 < sv.j ∧ sv.j < (I.vertices_num : Int))) →
    ∃ s1 B, merge_loop I fuel l s = some s1 ∧ Merged I s1 B ∧
      ((∀ a b : Int, 0 < a → a < (I.vertices_num : Int) → 0 < b → b < (I.vertices_num : Int) →
        I.cost a b ≤ I.cost a 0 + I.cost 0 b) → s1.solution_cost ≤ s.solution_cost)
  | [], s, A, h, _ => ⟨s, A, rfl, h, fun _ => le_refl _⟩
  | sv :: rest, s, A, h, hl => by
    obtain ⟨s1, B, e1, h1, c1⟩ := h.merge_step_inv sv (hl sv (List.mem_cons_self _ _)).1
      (hl sv (List.mem_cons_self _ _)).2 hf
    obtain ⟨s2, C, e2, h2, c2⟩ := Merged.merge_loop_inv hf rest s1 B h1
      (fun x hx => hl x (List.mem_cons_of_mem _ hx))
    refine ⟨s2, C, ?_, h2, fun htri => le_trans (c2 htri) (c1 htri)⟩
    simp only [merge_loop, e1, e2]

end Savings
namespace Savings

theorem savings_inner_mem (I : Instance) (lnum lden limit i : Int) : ∀ (rest : List Int)
    (added : Nat) (acc : List Saving) (sv : Saving),
    sv ∈ savings_inner I lnum lden limit i rest added acc →
    sv ∈ acc ∨ (sv.i = i ∧ sv.j ∈ rest ∧ i < sv.j)
  | [], _, _, sv, h => Or.inl h
  | j :: rest, added, acc, sv, h => by
    unfold savings_inner at h
    by_cases c1 : (added : Int) < limit
    · rw [if_pos c1] at h
      by_cases c2 : i < j
      · rw [if_pos c2] at h
        rcases savings_inner_mem I lnum lden limit i rest _ _ sv h with g | ⟨g1, g2, g3⟩
        · rcases List.mem_append.1 g with g | g
          · exact Or.inl g
          · have : sv = ⟨i, j, lden * (I.cost i 0 + I.cost 0 j) - lnum * I.cost i j⟩ := by
              simpa using g
            subst this
            exact Or.inr ⟨rfl, List.mem_cons_self _ _, c2⟩
        · exact Or.inr ⟨g1, List.mem_cons_of_mem _ g2, g3⟩
      · rw [if_neg c2] at h
        rcases savings_inner_mem I lnum lden limit i rest _ _ sv h with g | ⟨g1, g2, g3⟩
        · exact Or.inl g
        · exact Or.inr ⟨g1, List.mem_cons_of_mem _ g2, g3⟩
    · rw [if_neg c1] at h
      exact Or.inl h

theorem savings_outer_mem (I : Instance) (nb : Int → List Int) (lnum lden limit : Int) :
    ∀ (n : Nat) (sv : Saving), sv ∈ savings_outer I nb lnum lden limit n →
    0 < sv.i ∧ sv.i ≤ (n : Int) ∧ sv.j ∈ nb sv.i ∧ sv.i < sv.j
  | 0, sv, h => by cases h
  | n + 1, sv, h => by
    unfold savings_outer at h
    rcases savings_inner_mem I lnum lden limit _ _ _ _ sv h with g | ⟨g1, g2, g3⟩
    · obtain ⟨a, b, c, d⟩ := savings_outer_mem I nb lnum lden limit n sv g
      exact ⟨a, by push_cast; omega, c, d⟩
    · refine ⟨by omega, by push_cast; omega, ?_, by omega⟩
      rw [g1]
      exact List.mem_of_mem_tail g2

theorem sort_savings_perm (l : List Saving) : (sort_savings l).Perm l :=
  List.perm_insertionSort _ l

/-- A non-negative neighbour limit gives a non-negative number of savings. -/
theorem savings_num_nonneg {I : Instance} (hN : 1 ≤ I.vertices_num) {neighbors_num : Int}
    (hlim : 0 ≤ neighbors_num) : 0 ≤ savings_num I neighbors_num := by
  unfold savings_num
  rcases Nat.eq_or_lt_of_le hN with e | e
  · rw [← e]
    simp
  · exact mul_nonneg (by omega) (le_min (by omega) hlim)

/-- With a non-negative number of savings that fits the type `int` the call of `reserve`
returns, and the vector is filled and sorted. -/
theorem sorted_savings_some {I : Instance} (nb : Int → List Int) (lnum lden : Int)
    {neighbors_num : Int} (h0 : 0 ≤ savings_num I neighbors_num)
    (hfit : savings_num I neighbors_num < 2147483648) :
    sorted_savings I nb lnum lden neighbors_num =
      some (sort_savings (savings_outer I nb lnum lden
        ((min ((I.vertices_num : Int) - 1 - 1) neighbors_num) % 4294967296)
        (I.vertices_num - 1))) := by
  unfold sorted_savings
  rw [if_pos ⟨h0, hfit⟩]

/-- The savings join two customers. -/
theorem sorted_savings_mem {I : Instance} {nb : Int → List Int}
    (hnb : ∀ i : Int, 0 < i → i < (I.vertices_num : Int) → ∀ j ∈ nb i, j < (I.vertices_num : Int))
    (lnum lden neighbors_num : Int) (savings : List Saving)
    (hs : sorted_savings I nb lnum lden neighbors_num = some savings) (sv : Saving)
    (h : sv ∈ savings) :
    (0 < sv.i ∧ sv.i < (I.vertices_num : Int)) ∧ (0 < sv.j ∧ sv.j < (I.vertices_num : Int)) := by
  unfold sorted_savings at hs
  split_ifs at hs
  have hs2 := Option.some.inj hs
  rw [← hs2] at h
  have h2 := (sort_savings_perm _).mem_iff.1 h
  obtain ⟨a, b, c, d⟩ := savings_outer_mem I nb lnum lden _ _ sv h2
  have hi : sv.i < (I.vertices_num : Int) := by omega
  exact ⟨⟨a, hi⟩, ⟨by omega, hnb sv.i a hi sv.j c⟩⟩

/-- With a negative number of savings `clarke_and_wright` gives no solution, whatever the
fuel: `savings.reserve` throws. -/
theorem clarke_and_wright_throws (I : Instance) (nb : Int → List Int) (s : Solution)
    (lnum lden : Int) {neighbors_num : Int} (h : savings_num I neighbors_num < 0) (fuel : Nat) :
    clarke_and_wright I nb s lnum lden neighbors_num fuel = none := by
  have e : sorted_savings I nb lnum lden neighbors_num = none := by
    unfold sorted_savings
    rw [if_neg (fun c => by omega)]
  unfold clarke_and_wright
  rw [e]
  cases s.reset I fuel <;> rfl

/-- The solution with one route per customer satisfies the invariant of the merging
loop. -/
theorem singles_merged {I : Instance} {s : Solution} {n : Nat}
    (hn : n + 1 = I.vertices_num) (hR : Rep I s (singles n)) (hC : CostOK I s (singles n))
    (hdem : ∀ c : Int, 0 < c → c < (I.vertices_num : Int) → I.demand c ≤ I.vehicle_capacity) :
    Merged I s (singles n) := by
  refine ⟨hR, hC, fun r hr => ?_, fun c c0 c1 => ?_, fun r hr => ?_⟩
  · unfold singles at hr ⊢
    by_cases c : 0 < r ∧ r ≤ n
    · rw [if_pos c]
      exact ⟨[(r : Int)], rfl, by simp⟩
    · rw [if_neg c] at hr
      exact absurd rfl hr
  · refine ⟨c.toNat, ?_⟩
    unfold singles
    rw [if_pos ⟨by omega, by omega⟩]
    simp only [List.mem_cons, List.mem_singleton, List.not_mem_nil, or_false]
    right
    omega
  · unfold singles at hr ⊢
    by_cases c : 0 < r ∧ r ≤ n
    · rw [if_pos c]
      have hr0 : (r : Int) ≠ 0 := by omega
      rw [loadOf_cons, if_pos rfl, loadOf_cons, if_neg hr0, loadOf_nil]
      have := hdem (r : Int) (by omega) (by omega)
      omega
    · rw [if_neg c] at hr
      exact absurd rfl hr

/-- The function `clarke_and_wright` returns, on every consistent input solution, a
solution that satisfies the invariant of the merging loop; when the costs satisfy the
triangle inequality through the depot its cost is at most the cost of the one-customer
routes. -/
theorem clarke_and_wright_ok {I : Instance} (hsym : CostSym I) (hN : 1 ≤ I.vertices_num)
    {nb : Int → List Int}
    (hnb : ∀ i : Int, 0 < i → i < (I.vertices_num : Int) → ∀ j ∈ nb i, j < (I.vertices_num : Int))
    (hdem : ∀ c : Int, 0 < c → c < (I.vertices_num : Int) → I.demand c ≤ I.vehicle_capacity)
    {s : Solution} {A : Nat → List Int} (hR : Rep I s A)
    (hmax : s.max_number_routes = I.vertices_num + 1) {l : List Int} (hc : s.cache.Holds l)
    {fuel : Nat} (hf : l.length < fuel) (hf2 : I.vertices_num ≤ fuel)
    (lnum lden neighbors_num : Int) (hlim : 0 ≤ neighbors_num)
    (hfit : savings_num I neighbors_num < 2147483648) :
    ∃ s1 B, clarke_and_wright I nb s lnum lden neighbors_num fuel = some s1 ∧ Merged I s1 B ∧
      ((∀ a b : Int, 0 < a → a < (I.vertices_num : Int) → 0 < b → b < (I.vertices_num : Int) →
        I.cost a b ≤ I.cost a 0 + I.cost 0 b) →
        s1.solution_cost ≤ singles_cost I (I.vertices_num - 1)) := by
  obtain ⟨s0, e0, r0, c0, m0, b0, p0, a0, z0⟩ := reset_rep hR hmax hc hf
  have hn : I.vertices_num - 1 + 1 = I.vertices_num := by omega
  obtain ⟨i1, i2, _, _, _, i6, _⟩ :=
    build_all_spec hsym r0 c0 m0 b0 p0 a0 z0 (I.vertices_num - 1) (by omega)
  have hM := singles_merged hn i1 i2 hdem
  have hs := sorted_savings_some nb lnum lden (savings_num_nonneg hN hlim) hfit
  obtain ⟨s1, B, e1, h1, c1⟩ := Merged.merge_loop_inv hf2 _ _ _ hM
    (fun sv hsv => sorted_savings_mem hnb lnum lden neighbors_num _ hs sv hsv)
  refine ⟨s1, B, ?_, h1, fun htri => ?_⟩
  · unfold clarke_and_wright
    rw [e0, hs]
    exact e1
  · rw [← i6]
    exact c1 htri

end Savings
namespace SparseIntSet

theorem insert_flags_iff (s : SparseIntSet) (x u : Int) :
    (s.insert x).flags u = true ↔ s.flags u = true ∨ u = x := by
  unfold insert contains
  by_cases c : s.flags x = true
  · rw [if_pos c]
    constructor
    · exact fun h => Or.inl h
    · rintro (h | h)
      · exact h
      · rw [h]; exact c
  · rw [if_neg c]
    simp only [insert_without_checking_existance, upd]
    by_cases e : u = x
    · simp [e]
    · simp [e]

end SparseIntSet

namespace RuinAndRecreate

theorem jump_spec (nb : Int → List Int) (s : Solution) (routes : SparseIntSet) (unvisited : Bool)
    (curr : Int) :
    jump nb s routes unvisited curr = -1 ∨
    (jump nb s routes unvisited curr ∈ (nb curr).tail ∧ jump nb s routes unvisited curr ≠ 0 ∧
      s.is_customer_in_solution (jump nb s routes unvisited curr) = true) := by
  unfold jump
  cases h : (nb curr).tail.find? (fun neighbor =>
      !(decide (neighbor = 0) || !(s.is_customer_in_solution neighbor) ||
        (unvisited && routes.contains ((s.get_route_index neighbor : Nat) : Int)))) with
  | none => exact Or.inl rfl
  | some n =>
    right
    have h1 := List.find?_some h
    have h2 := List.mem_of_find?_eq_some h
    simp only [Bool.not_eq_true', Bool.or_eq_false_iff, decide_eq_false_iff_not,
      Bool.not_eq_false', Bool.and_eq_false_imp] at h1
    exact ⟨h2, h1.1.1, h1.1.2⟩

theorem arrange_perm (I : Instance) (strategy : Nat) (shuffle : List Int → List Int)
    (hsh : ∀ l, (shuffle l).Perm l) (removed : List Int) :
    (arrange I strategy shuffle removed).Perm removed := by
  unfold arrange
  split
  · exact hsh removed
  · exact List.perm_insertionSort _ _
  · exact List.perm_insertionSort _ _
  · exact List.perm_insertionSort _ _
  · exact List.Perm.refl _

/-- The set of candidate routes: the routes of the neighbours of `customer` that are
customers of the solution. -/
theorem collect_spec (nb : Int → List Int) (s : Solution) {routes : SparseIntSet}
    (h : routes.OK) (customer : Int) :
    (collect nb s routes customer).OK ∧
    ∀ v, v ∈ (collect nb s routes customer).get_elements ↔
      ∃ n ∈ (nb customer).tail, n ≠ 0 ∧ s.is_customer_in_solution n = true ∧
        ((s.get_route_index n : Nat) : Int) = v := by
  unfold collect
  obtain ⟨c1, c2, c3⟩ := SparseIntSet.clear_spec h
  have key : ∀ (l : List Int) (rs : SparseIntSet), rs.OK →
      (l.foldl (fun (rs : SparseIntSet) (wh : Int) =>
        if wh = 0 ∨ s.is_customer_in_solution wh = false then rs
        else rs.insert ((s.get_route_index wh : Nat) : Int)) rs).OK ∧
      ∀ v, v ∈ (l.foldl (fun (rs : SparseIntSet) (wh : Int) =>
        if wh = 0 ∨ s.is_customer_in_solution wh = false then rs
        else rs.insert ((s.get_route_index wh : Nat) : Int)) rs).elements ↔
        (v ∈ rs.elements ∨ ∃ n ∈ l, n ≠ 0 ∧ s.is_customer_in_solution n = true ∧
          ((s.get_route_index n : Nat) : Int) = v) := by
    intro l
    induction l with
    | nil =>
      intro rs hrs
      simp only [List.foldl_nil, List.not_mem_nil, false_and, exists_false, or_false]
      exact ⟨hrs, fun v => trivial⟩
    | cons x l ih =>
      intro rs hrs
      simp only [List.foldl_cons]
      by_cases c : x = 0 ∨ s.is_customer_in_solution x = false
      · rw [if_pos c]
        obtain ⟨i1, i2⟩ := ih rs hrs
        refine ⟨i1, fun v => ?_⟩
        rw [i2 v]
        constructor
        · rintro (g | ⟨n, n1, n2, n3, n4⟩)
          · exact Or.inl g
          · exact Or.inr ⟨n, List.mem_cons_of_mem _ n1, n2, n3, n4⟩
        · rintro (g | ⟨n, n1, n2, n3, n4⟩)
          · exact Or.inl g
          · rcases List.mem_cons.1 n1 with e | e
            · subst e
              rcases c with c | c
              · exact absurd c n2
              · rw [c] at n3; cases n3
            · exact Or.inr ⟨n, e, n2, n3, n4⟩
      · rw [if_neg c]
        have hx0 : x ≠ 0 := fun g => c (Or.inl g)
        have hxs : s.is_customer_in_solution x = true := by
          cases hh : s.is_customer_in_solution x
          · exact absurd (Or.inr hh) c
          · rfl
        obtain ⟨j1, j2, j3⟩ := SparseIntSet.insert_set_ok hrs ((s.get_route_index x : Nat) : Int)
        obtain ⟨i1, i2⟩ := ih _ j1
        refine ⟨i1, fun v => ?_⟩
        rw [i2 v, ← j1 v, SparseIntSet.insert_flags_iff, hrs v]
        constructor
        · rintro ((g | g) | ⟨n, n1, n2, n3, n4⟩)
          · exact Or.inl g
          · exact Or.inr ⟨x, List.mem_cons_self _ _, hx0, hxs, g.symm⟩
          · exact Or.inr ⟨n, List.mem_cons_of_mem _ n1, n2, n3, n4⟩
        · rintro (g | ⟨n, n1, n2, n3, n4⟩)
          · exact Or.inl (Or.inl g)
          · rcases List.mem_cons.1 n1 with e | e
            · subst e
              exact Or.inl (Or.inr n4.symm)
            · exact Or.inr ⟨n, e, n2, n3, n4⟩
  obtain ⟨k1, k2⟩ := key (nb customer).tail routes.clear c3
  refine ⟨k1, fun v => ?_⟩
  show v ∈ (List.foldl _ routes.clear (nb customer).tail).elements ↔ _
  rw [k2 v, c2]
  simp

end RuinAndRecreate
namespace RuinAndRecreate

section Choose

variable {I : Instance} {s : Solution} {A : Nat → List Int}

/-- In a route with more than one customer the successor of a customer, the depot being
skipped, is another customer of the route. -/
theorem next_in_route (hR : Rep I s A) {route : Nat} {curr : Int} (hc : curr ∈ A route)
    (hc0 : curr ≠ 0) (hsz : 1 < sizeOf (A route)) :
    (if s.get_next_customer_vertex curr = 0 then
        s.get_next_vertex route (s.get_next_customer_vertex curr)
      else s.get_next_customer_vertex curr) ≠ 0 ∧
    (if s.get_next_customer_vertex curr = 0 then
        s.get_next_vertex route (s.get_next_customer_vertex curr)
      else s.get_next_customer_vertex curr) ≠ curr ∧
    (if s.get_next_customer_vertex curr = 0 then
        s.get_next_vertex route (s.get_next_customer_vertex curr)
      else s.get_next_customer_vertex curr) ∈ A route := by
  have e1 : s.get_next_customer_vertex curr = s.get_next_vertex route curr :=
    (Solution.get_next_vertex_ne s route hc0).symm
  rw [e1]
  obtain ⟨t, ht⟩ := exists_rotated_cons hc
  have hnd : (curr :: t).Nodup := ht.nodup_iff.1 (hR.routes route).nodup
  have hsz2 : 1 < sizeOf (curr :: t) := by rw [← sizeOf_perm ht.perm]; exact hsz
  cases t with
  | nil =>
    rw [sizeOf_cons, if_neg hc0] at hsz2
    simp at hsz2
  | cons x t2 =>
    obtain ⟨a1, _⟩ := (hR.routes route).adjacent ht
    rw [a1]
    by_cases hx : x = 0
    · subst hx
      rw [if_pos rfl]
      cases t2 with
      | nil =>
        rw [sizeOf_cons, if_neg hc0, sizeOf_cons, if_pos rfl] at hsz2
        simp at hsz2
      | cons y t3 =>
        have hrot : A route ~r (0 :: y :: (t3 ++ [curr])) := by
          refine ht.trans ?_
          have := @List.isRotated_append Int [curr] (0 :: y :: t3)
          simpa using this
        obtain ⟨b1, _⟩ := (hR.routes route).adjacent hrot
        rw [b1]
        simp only [List.nodup_cons, List.mem_cons, not_or] at hnd
        refine ⟨fun g => hnd.2.1.1 g.symm, fun g => hnd.1.2.1 g.symm, ?_⟩
        exact ht.mem_iff.2 (by simp)
    · rw [if_neg hx]
      simp only [List.nodup_cons, List.mem_cons, not_or] at hnd
      exact ⟨hx, fun g => hnd.1.1 g.symm, ht.mem_iff.2 (by simp)⟩

/-- In a route with more than one customer the predecessor of a customer, the depot being
skipped, is another customer of the route. -/
theorem prev_in_route (hR : Rep I s A) {route : Nat} {curr : Int} (hc : curr ∈ A route)
    (hc0 : curr ≠ 0) (hsz : 1 < sizeOf (A route)) :
    (if s.get_prev_customer_vertex curr = 0 then
        s.get_prev_vertex route (s.get_prev_customer_vertex curr)
      else s.get_prev_customer_vertex curr) ≠ 0 ∧
    (if s.get_prev_customer_vertex curr = 0 then
        s.get_prev_vertex route (s.get_prev_customer_vertex curr)
      else s.get_prev_customer_vertex curr) ≠ curr ∧
    (if s.get_prev_customer_vertex curr = 0 then
        s.get_prev_vertex route (s.get_prev_customer_vertex curr)
      else s.get_prev_customer_vertex curr) ∈ A route := by
  have e1 : s.get_prev_customer_vertex curr = s.get_prev_vertex route curr := by
    unfold Solution.get_prev_customer_vertex Solution.get_prev_vertex
    rw [if_neg hc0]
  rw [e1]
  obtain ⟨t, ht⟩ := exists_rotated_cons hc
  have hnd : (curr :: t).Nodup := ht.nodup_iff.1 (hR.routes route).nodup
  have hsz2 : 1 < sizeOf (curr :: t) := by rw [← sizeOf_perm ht.perm]; exact hsz
  obtain ⟨a1, _⟩ := prev_of_rep hR ht
  rw [a1]
  rcases List.eq_nil_or_concat t with e | ⟨t0, p, e⟩
  · subst e
    rw [sizeOf_cons, if_neg hc0] at hsz2
    simp at hsz2
  · rw [List.concat_eq_append] at e
    subst e
    have hl : lastFrom curr (t0 ++ [p]) = p := by simp
    rw [hl]
    by_cases hp : p = 0
    · subst hp
      rw [if_pos rfl]
      rcases List.eq_nil_or_concat t0 with e | ⟨t1, p2, e⟩
      · subst e
        rw [sizeOf_cons, if_neg hc0] at hsz2
        simp [sizeOf_cons] at hsz2
      · rw [List.concat_eq_append] at e
        subst e
        have hrot : A route ~r (0 :: (curr :: (t1 ++ [p2]))) := by
          refine ht.trans ?_
          have := @List.isRotated_append Int (curr :: (t1 ++ [p2])) [0]
          simpa using this
        obtain ⟨b1, _⟩ := prev_of_rep hR hrot
        rw [b1]
        have hl2 : lastFrom 0 (curr :: (t1 ++ [p2])) = p2 := by simp
        rw [hl2]
        have hm : p2 ∈ A route := ht.mem_iff.2 (by simp)
        have hnd2 : (0 :: (curr :: (t1 ++ [p2]))).Nodup := hrot.nodup_iff.1 (hR.routes route).nodup
        simp only [List.nodup_cons, List.mem_cons, List.mem_append, List.mem_singleton,
          not_or] at hnd2
        exact ⟨fun g => hnd2.1.2.2.1 g.symm, fun g => hnd2.2.1.2.1 g.symm, hm⟩
    · rw [if_neg hp]
      have hm : p ∈ A route := ht.mem_iff.2 (by simp)
      simp only [List.nodup_cons, List.mem_append, List.mem_singleton, not_or] at hnd
      exact ⟨hp, fun g => hnd.1.2 g.symm, hm⟩

/-- The next customer to remove is the dummy vertex or a customer of the solution other
than `curr`. -/
theorem choose_next_spec (hR : Rep I s A) (nb : Int → List Int) (routes : SparseIntSet)
    (c1 c2 : Bool) {route : Nat} {curr : Int} (hc : curr ∈ A route) (hc0 : curr ≠ 0)
    (hnb : curr ∉ (nb curr).tail) :
    choose_next nb s routes c1 c2 route curr = -1 ∨
    (choose_next nb s routes c1 c2 route curr ≠ 0 ∧
      choose_next nb s routes c1 c2 route curr ≠ curr ∧
      ∃ r, choose_next nb s routes c1 c2 route curr ∈ A r) := by
  unfold choose_next
  by_cases h : s.get_route_size route > 1 ∧ c1 = true
  · rw [if_pos h]
    have hsz : 1 < sizeOf (A route) := by
      rw [← (hR.routes route).size (List.ne_nil_of_mem hc)]
      exact h.1
    right
    by_cases h2 : c2 = true
    · rw [if_pos h2]
      obtain ⟨a1, a2, a3⟩ := next_in_route hR hc hc0 hsz
      exact ⟨a1, a2, route, a3⟩
    · rw [if_neg h2]
      obtain ⟨a1, a2, a3⟩ := prev_in_route hR hc hc0 hsz
      exact ⟨a1, a2, route, a3⟩
  · rw [if_neg h]
    rcases jump_spec nb s routes c2 curr with g | ⟨g1, g2, g3⟩
    · exact Or.inl g
    · right
      refine ⟨g2, fun e => hnb (by rw [e] at g1; exact g1),
        (s.customers_list (jump nb s routes c2 curr)).route_ptr,
        ?_⟩
      unfold Solution.is_customer_in_solution at g3
      simp only [decide_eq_true_eq] at g3
      exact ((hR.routes _).mem_iff _ g2).2 ⟨rfl, g3⟩

end Choose

end RuinAndRecreate
namespace RuinAndRecreate

section Ruin

variable {I : Instance} {fuel : Nat} {s : Solution} {A : Nat → List Int}

theorem only_depot {t : List Int} (hnd : t.Nodup) (h0 : (0 : Int) ∈ t)
    (hall : ¬ ∃ c ∈ t, c ≠ 0) : t = [0] := by
  have hz : ∀ c ∈ t, c = 0 := by
    intro c hc
    by_contra g
    exact hall ⟨c, hc, g⟩
  cases t with
  | nil => cases h0
  | cons x t2 =>
    have hx := hz x (List.mem_cons_self _ _)
    subst hx
    cases t2 with
    | nil => rfl
    | cons y t3 =>
      have hy := hz y (by simp)
      subst hy
      simp at hnd

/-- One removal of the ruin phase: the customer `curr` leaves its route, and the route
leaves the solution when `curr` was its only customer. The solution stays sound. -/
theorem ruin_step_sound (hsym : CostSym I) (hf : I.vertices_num < fuel)
    (hpos : ∀ c, 0 < c → c < (I.vertices_num : Int) → 0 < I.demand c)
    (F : Sound I fuel s A) {curr : Int} (hc0 : curr ≠ 0)
    (hc : curr ∈ A (s.get_route_index curr)) :
    ∃ B, Sound I fuel
        (if (Solution.remove_vertex I s true (s.get_route_index curr) curr).1.is_route_empty
            (s.get_route_index curr) = true then
          (Solution.remove_vertex I s true (s.get_route_index curr) curr).1.remove_route true
            (s.get_route_index curr)
         else (Solution.remove_vertex I s true (s.get_route_index curr) curr).1) B ∧
      (∀ r, curr ∉ B r) ∧ (∀ v, v ≠ 0 → v ≠ curr → ∀ r, (v ∈ B r ↔ v ∈ A r)) := by
  generalize hroute : s.get_route_index curr = route at hc ⊢
  obtain ⟨hR, _⟩ := F.mutated.inv hsym hf
  have hne : A route ≠ [] := List.ne_nil_of_mem hc
  have h0 := F.depot route hne
  obtain ⟨t, ht⟩ := exists_rotated_cons hc
  have hnd : (curr :: t).Nodup := ht.nodup_iff.1 (hR.routes route).nodup
  have h0t : (0 : Int) ∈ t := by
    have := ht.mem_iff.1 h0
    rcases List.mem_cons.1 this with e | e
    · exact absurd e.symm hc0
    · exact e
  have htne : t ≠ [] := List.ne_nil_of_mem h0t
  have M1 := Mutated.remove true route curr t (Mutated.rotate route (curr :: t) F.mutated ht)
    (upd_same _ _ _) htne
  rw [upd_upd] at M1
  obtain ⟨hR1, _⟩ := M1.inv hsym hf
  have hload : ((Solution.remove_vertex I s true route curr).1.routes_list route).load =
      loadOf I t := by
    have := (hR1.routes route).load (by rw [upd_same]; exact htne)
    rw [upd_same] at this
    exact this
  have hposT : ∀ v ∈ t, v ≠ 0 → 0 < I.demand v := by
    intro v hv hv0
    have hm : v ∈ A route := ht.mem_iff.2 (List.mem_cons_of_mem _ hv)
    obtain ⟨r1, r2⟩ := (hR.routes route).range v hm
    exact hpos v (by omega) r2
  have hcurT : curr ∉ t := (List.nodup_cons.1 hnd).1
  have hother : ∀ r, r ≠ route → curr ∉ A r := by
    intro r hr hm
    have e1 := (hR.route_of_mem hc0 hm).1
    have e2 := (hR.route_of_mem hc0 hc).1
    exact hr (e1.symm.trans e2)
  have hcap : loadOf I t ≤ I.vehicle_capacity := by
    have c1 := F.cap route
    rw [loadOf_perm I ht.perm, loadOf_cons, if_neg hc0] at c1
    obtain ⟨r1, r2⟩ := (hR.routes route).range curr hc
    have := hpos curr (by omega) r2
    omega
  by_cases hcust : ∃ c ∈ t, c ≠ 0
  · have hp := loadOf_pos t hposT hcust
    have hemp : (Solution.remove_vertex I s true route curr).1.is_route_empty route = false := by
      unfold Solution.is_route_empty
      rw [hload]
      simp only [decide_eq_false_iff_not]
      omega
    rw [hemp]
    simp only [Bool.false_eq_true, if_false]
    refine ⟨upd A route t, ⟨M1, fun r hr => ?_, fun r hr => ?_, fun r => ?_⟩, fun r => ?_,
      fun v hv0 hvc r => ?_⟩
    · by_cases e : r = route
      · subst e; rw [upd_same]; exact h0t
      · rw [upd_other _ _ _ _ e] at hr ⊢; exact F.depot r hr
    · by_cases e : r = route
      · subst e; rw [upd_same]; exact hcust
      · rw [upd_other _ _ _ _ e] at hr ⊢; exact F.full r hr
    · by_cases e : r = route
      · subst e; rw [upd_same]; exact hcap
      · rw [upd_other _ _ _ _ e]; exact F.cap r
    · by_cases e : r = route
      · subst e; rw [upd_same]; exact hcurT
      · rw [upd_other _ _ _ _ e]; exact hother r e
    · by_cases e : r = route
      · subst e
        rw [upd_same, ht.mem_iff]
        simp [hvc]
      · rw [upd_other _ _ _ _ e]
  · have ht0 : t = [0] := only_depot (List.nodup_cons.1 hnd).2 h0t hcust
    have hemp : (Solution.remove_vertex I s true route curr).1.is_route_empty route = true := by
      unfold Solution.is_route_empty
      rw [hload, ht0]
      simp [loadOf, custs]
    rw [hemp]
    simp only [if_true]
    have M2 := Mutated.remove_route true route M1 (by rw [upd_same]; exact ht0)
    rw [upd_upd] at M2
    refine ⟨upd A route [], ⟨M2, fun r hr => ?_, fun r hr => ?_, fun r => ?_⟩, fun r => ?_,
      fun v hv0 hvc r => ?_⟩
    · by_cases e : r = route
      · subst e; rw [upd_same] at hr; exact absurd rfl hr
      · rw [upd_other _ _ _ _ e] at hr ⊢; exact F.depot r hr
    · by_cases e : r = route
      · subst e; rw [upd_same] at hr; exact absurd rfl hr
      · rw [upd_other _ _ _ _ e] at hr ⊢; exact F.full r hr
    · by_cases e : r = route
      · subst e
        rw [upd_same]
        have := F.cap r
        have hn := loadOf_nonneg (I := I) [0] (by simp)
        rw [← ht0] at hn
        simp only [loadOf_nil]
        omega
      · rw [upd_other _ _ _ _ e]; exact F.cap r
    · by_cases e : r = route
      · subst e; rw [upd_same]; simp
      · rw [upd_other _ _ _ _ e]; exact hother r e
    · by_cases e : r = route
      · subst e
        rw [upd_same, ht.mem_iff, ht0]
        simp [hvc, hv0]
      · rw [upd_other _ _ _ _ e]

end Ruin

end RuinAndRecreate
namespace RuinAndRecreate

/-- The ruin loop: the solution stays sound, the removed customers are distinct customers
that are no longer served, at most one per iteration, and the other customers stay where
they are. -/
theorem ruin_sound {I : Instance} {fuel : Nat} (hsym : CostSym I) (hf : I.vertices_num < fuel)
    (hpos : ∀ c, 0 < c → c < (I.vertices_num : Int) → 0 < I.demand c)
    (nb : Int → List Int) (hnb : ∀ c, c ∉ (nb c).tail) (coin1 coin2 : Nat → Bool) :
    ∀ (m n : Nat) (s : Solution) (A : Nat → List Int) (removed : List Int)
      (routes : SparseIntSet) (curr : Int),
    Sound I fuel s A → curr ≠ 0 → (∃ r, curr ∈ A r) → removed.Nodup →
    (∀ v ∈ removed, v ≠ 0 ∧ ∀ r, v ∉ A r) → routes.OK →
    ∃ B, Sound I fuel (ruin I nb coin1 coin2 m n s removed routes curr).1 B ∧
      (ruin I nb coin1 coin2 m n s removed routes curr).2.1.Nodup ∧
      (ruin I nb coin1 coin2 m n s removed routes curr).2.1.length ≤ removed.length + m ∧
      (∀ v ∈ (ruin I nb coin1 coin2 m n s removed routes curr).2.1, v ≠ 0 ∧ ∀ r, v ∉ B r) ∧
      (∀ v, v ≠ 0 → v ∉ (ruin I nb coin1 coin2 m n s removed routes curr).2.1 →
        ∀ r, (v ∈ B r ↔ v ∈ A r)) ∧
      (∀ v ∈ (ruin I nb coin1 coin2 m n s removed routes curr).2.1,
        v ∈ removed ∨ ∃ r, v ∈ A r) ∧
      (∀ v ∈ removed, v ∈ (ruin I nb coin1 coin2 m n s removed routes curr).2.1) ∧
      (ruin I nb coin1 coin2 m n s removed routes curr).2.2.OK
  | 0, n, s, A, removed, routes, curr, F, _, _, hnd, hrem, hok => by
    refine ⟨A, F, hnd, le_refl _, hrem, fun v _ _ r => Iff.rfl, fun v hv => Or.inl hv,
      fun v hv => hv, hok⟩
  | m + 1, n, s, A, removed, routes, curr, F, hc0, ⟨r0, hr0⟩, hnd, hrem, hok => by
    obtain ⟨hR, _⟩ := F.mutated.inv hsym hf
    have hri : s.get_route_index curr = r0 := (hR.route_of_mem hc0 hr0).1
    have hc : curr ∈ A (s.get_route_index curr) := by rw [hri]; exact hr0
    obtain ⟨B1, F1, b1, b2⟩ := ruin_step_sound hsym hf hpos F hc0 hc
    have hnext := choose_next_spec hR nb (routes.insert ((s.get_route_index curr : Nat) : Int))
      (coin1 n) (coin2 n) hc hc0 (hnb curr)
    obtain ⟨k1, _, _⟩ := SparseIntSet.insert_set_ok hok ((s.get_route_index curr : Nat) : Int)
    have hcr : curr ∉ removed := fun g => (hrem curr g).2 r0 hr0
    have hnd1 : (removed ++ [curr]).Nodup := by
      rw [List.nodup_append]
      refine ⟨hnd, by simp, ?_⟩
      intro a ha hb
      simp only [List.mem_singleton] at hb
      subst hb
      exact hcr ha
    have hrem1 : ∀ v ∈ removed ++ [curr], v ≠ 0 ∧ ∀ r, v ∉ B1 r := by
      intro v hv
      rcases List.mem_append.1 hv with g | g
      · obtain ⟨g1, g2⟩ := hrem v g
        refine ⟨g1, fun r hm => g2 r ((b2 v g1 (fun e => hcr (e ▸ g)) r).1 hm)⟩
      · simp only [List.mem_singleton] at g
        subst g
        exact ⟨hc0, b1⟩
    unfold ruin
    simp only
    by_cases hn : choose_next nb s (routes.insert ((s.get_route_index curr : Nat) : Int))
        (coin1 n) (coin2 n) (s.get_route_index curr) curr = -1
    · rw [if_pos hn]
      refine ⟨B1, F1, hnd1, by simp, hrem1, fun v hv0 hv r => ?_, fun v hv => ?_,
        fun v hv => List.mem_append_left _ hv, k1⟩
      · refine b2 v hv0 (fun e => hv ?_) r
        simp [e]
      · rcases List.mem_append.1 hv with g | g
        · exact Or.inl g
        · simp only [List.mem_singleton] at g
          subst g
          exact Or.inr ⟨r0, hr0⟩
    · rw [if_neg hn]
      rcases hnext with g | ⟨g1, g2, ⟨r1, g3⟩⟩
      · exact absurd g hn
      · generalize choose_next nb s (routes.insert ((s.get_route_index curr : Nat) : Int))
          (coin1 n) (coin2 n) (s.get_route_index curr) curr = next at g1 g2 g3 ⊢
        obtain ⟨B, i1, i2, i3, i4, i5, i6, i7, i8⟩ := ruin_sound hsym hf hpos nb hnb coin1 coin2 m
          (n + 1) _ B1 (removed ++ [curr]) _ next F1 g1 ⟨r1, (b2 next g1 g2 r1).2 g3⟩ hnd1
          hrem1 k1
        refine ⟨B, i1, i2, ?_, i4, fun v hv0 hv r => ?_, fun v hv => ?_,
          fun v hv => i7 v (List.mem_append_left _ hv), i8⟩
        · simp only [List.length_append, List.length_singleton] at i3
          omega
        · have hvc : v ≠ curr := fun e => hv (i7 v (by simp [e]))
          exact (i5 v hv0 hv r).trans (b2 v hv0 hvc r)
        · rcases i6 v hv with g | ⟨r, g⟩
          · rcases List.mem_append.1 g with g | g
            · exact Or.inl g
            · simp only [List.mem_singleton] at g
              subst g
              exact Or.inr ⟨r0, hr0⟩
          · by_cases e : v = curr
            · subst e
              exact Or.inr ⟨r0, hr0⟩
            · have hv0 : v ≠ 0 := (i4 v hv).1
              exact Or.inr ⟨r, (b2 v hv0 e r).1 g⟩

end RuinAndRecreate
namespace RuinAndRecreate

theorem BestOK.improve_ok {cost : Nat → Int → Int} {Seen : Nat → Int → Prop} {b : Best}
    (h : BestOK cost Seen b) (r : Nat) (w : Int) {c : Int} (hc : cost r w = c) :
    BestOK cost (fun r2 w2 => Seen r2 w2 ∨ (r2 = r ∧ w2 = w)) (b.improve c r w) := by
  unfold Best.improve
  obtain ⟨h1, h2⟩ := h
  cases hb : b.cost with
  | none =>
    have e : below c none = true := rfl
    rw [e, if_pos rfl]
    obtain ⟨_, n2⟩ := h1 hb
    refine ⟨fun g => (by cases g), fun c2 g => ?_⟩
    simp only [Option.some.injEq] at g
    subst g
    refine ⟨Or.inr ⟨rfl, rfl⟩, hc, fun r2 w2 g2 => ?_⟩
    rcases g2 with g2 | ⟨g2, g3⟩
    · exact absurd g2 (n2 r2 w2)
    · rw [g2, g3, hc]
  | some c0 =>
    obtain ⟨s1, s2, s3⟩ := h2 c0 hb
    by_cases hlt : c < c0
    · have e : below c (some c0) = true := by simp [below, hlt]
      rw [e, if_pos rfl]
      refine ⟨fun g => (by cases g), fun c2 g => ?_⟩
      simp only [Option.some.injEq] at g
      subst g
      refine ⟨Or.inr ⟨rfl, rfl⟩, hc, fun r2 w2 g2 => ?_⟩
      rcases g2 with g2 | ⟨g2, g3⟩
      · have := s3 r2 w2 g2
        omega
      · rw [g2, g3, hc]
    · have e : below c (some c0) = false := by simp [below, hlt]
      rw [e]
      simp only [Bool.false_eq_true, if_false]
      refine ⟨fun g => (by rw [hb] at g; cases g), fun c2 g => ?_⟩
      rw [hb] at g
      simp only [Option.some.injEq] at g
      subst g
      refine ⟨Or.inl s1, s2, fun r2 w2 g2 => ?_⟩
      rcases g2 with g2 | ⟨g2, g3⟩
      · exact s3 r2 w2 g2
      · rw [g2, g3, hc]
        omega

theorem BestOK.same_seen {cost : Nat → Int → Int} {Seen Seen2 : Nat → Int → Prop} {b : Best}
    (h : BestOK cost Seen b) (he : ∀ r w, Seen r w ↔ Seen2 r w) : BestOK cost Seen2 b := by
  obtain ⟨h1, h2⟩ := h
  refine ⟨fun g => ⟨(h1 g).1, fun r w g2 => (h1 g).2 r w ((he r w).2 g2)⟩, fun c g => ?_⟩
  obtain ⟨s1, s2, s3⟩ := h2 c g
  exact ⟨(he _ _).1 s1, s2, fun r w g2 => s3 r w ((he r w).2 g2)⟩

section Scan

variable {I : Instance} {s : Solution} {A : Nat → List Int}

/-- The cost that the scan computes for the position before the customer `w` of route
`r`. -/
theorem scan_cost_customer (hR : Rep I s A) (customer : Int) {r : Nat} {w : Int}
    (hw : w ∈ A r) (hw0 : w ≠ 0) :
    - s.get_cost_prev_customer w + I.cost (s.get_prev_customer_vertex w) customer +
      I.cost customer w = insertion_cost I s customer r w := by
  have hc := (hR.routes r).cycle (List.ne_nil_of_mem hw)
  obtain ⟨_, _, _, _, f5⟩ := IsCycle_facts hc w hw
  have e1 : s.get_cost_prev_customer w = s.get_cost_prev_vertex r w := by
    simp [Solution.get_cost_prev_customer, Solution.get_cost_prev_vertex, hw0]
  have e2 : s.get_prev_customer_vertex w = s.get_prev_vertex r w := by
    simp [Solution.get_prev_customer_vertex, Solution.get_prev_vertex, hw0]
  rw [e1, e2, f5]
  unfold insertion_cost
  ring

/-- The cost that the scan computes for the position at the end of route `r`. -/
theorem scan_cost_depot (hR : Rep I s A) (customer : Int) {r : Nat} (hw : (0 : Int) ∈ A r) :
    - s.get_cost_prev_depot r + I.cost (s.get_last_customer r) customer + I.cost customer 0 =
      insertion_cost I s customer r 0 := by
  have hc := (hR.routes r).cycle (List.ne_nil_of_mem hw)
  obtain ⟨_, _, _, _, f5⟩ := IsCycle_facts hc 0 hw
  have e1 : s.get_cost_prev_depot r = s.get_cost_prev_vertex r 0 := by
    simp [Solution.get_cost_prev_depot, Solution.get_cost_prev_vertex]
  have e2 : s.get_last_customer r = s.get_prev_vertex r 0 := by
    simp [Solution.get_last_customer, Solution.get_prev_vertex]
  rw [e1, e2, f5]
  unfold insertion_cost
  ring

/-- The loop over the customers of a route tries the position before each of them. -/
theorem scan_customers_chain (hR : Rep I s A) (customer : Int) (r : Nat) :
    ∀ (l : List Int) (x : Int) (fuel : Nat) (b : Best) (Seen : Nat → Int → Prop),
      l.length + 1 < fuel → NextChain (fun u => (s.customers_list u).next) x l 0 →
      (∀ u ∈ x :: l, u ≠ 0 ∧ u ∈ A r) → BestOK (insertion_cost I s customer) Seen b →
      ∃ b2, scan_customers I s customer r fuel x b = some b2 ∧
        BestOK (insertion_cost I s customer)
          (fun r2 w2 => Seen r2 w2 ∨ (r2 = r ∧ w2 ∈ x :: l)) b2 := by
  intro l
  induction l with
  | nil =>
    intro x fuel b Seen hf hc hx hb
    obtain ⟨f, rfl⟩ : ∃ f, fuel = f + 2 := ⟨fuel - 2, by simp at hf; omega⟩
    simp only [NextChain] at hc
    obtain ⟨x0, xA⟩ := hx x (by simp)
    have h1 := hb.improve_ok r x (scan_cost_customer hR customer xA x0).symm
    refine ⟨_, ?_, h1.same_seen (fun r2 w2 => by simp)⟩
    simp only [scan_customers, if_neg x0]
    have e : s.get_next_customer_vertex x = 0 := hc
    rw [e]
    simp
  | cons y l ih =>
    intro x fuel b Seen hf hc hx hb
    obtain ⟨f, rfl⟩ : ∃ f, fuel = f + 1 := ⟨fuel - 1, by simp at hf; omega⟩
    simp only [NextChain] at hc
    obtain ⟨x0, xA⟩ := hx x (by simp)
    have h1 := hb.improve_ok r x (scan_cost_customer hR customer xA x0).symm
    obtain ⟨b2, i1, i2⟩ := ih y f _ _ (by simp at hf ⊢; omega) hc.2
      (fun u hu => hx u (List.mem_cons_of_mem _ hu)) h1
    refine ⟨b2, ?_, i2.same_seen (fun r2 w2 => ?_)⟩
    · simp only [scan_customers, if_neg x0]
      have e : s.get_next_customer_vertex x = y := hc.1
      rw [e]
      exact i1
    · simp only [List.mem_cons]
      constructor
      · rintro ((g | ⟨g1, g2⟩) | ⟨g1, g2⟩)
        · exact Or.inl g
        · exact Or.inr ⟨g1, Or.inl g2⟩
        · exact Or.inr ⟨g1, Or.inr g2⟩
      · rintro (g | ⟨g1, g2 | g2⟩)
        · exact Or.inl (Or.inl g)
        · exact Or.inl (Or.inr ⟨g1, g2⟩)
        · exact Or.inr ⟨g1, g2⟩

/-- The scan of a candidate route returns, and it has tried every position of the route
when the route has room for the customer, and none otherwise. -/
theorem scan_route_spec (hR : Rep I s A) (customer : Int) {fuel : Nat}
    (hf : I.vertices_num < fuel) {r : Nat} (h0 : (0 : Int) ∈ A r) {b : Best}
    {Seen : Nat → Int → Prop} (hb : BestOK (insertion_cost I s customer) Seen b) :
    ∃ b2, scan_route I s customer fuel b r = some b2 ∧
      BestOK (insertion_cost I s customer)
        (fun r2 w2 => Seen r2 w2 ∨ (r2 = r ∧
          s.get_route_load r + I.demand customer ≤ I.vehicle_capacity ∧
          (w2 = 0 ∨ s.get_route_index w2 = r))) b2 := by
  unfold scan_route
  by_cases hfit : s.get_route_load r + I.demand customer > I.vehicle_capacity
  · rw [if_pos hfit]
    refine ⟨b, rfl, hb.same_seen (fun r2 w2 => ?_)⟩
    constructor
    · exact fun g => Or.inl g
    · rintro (g | ⟨_, g, _⟩)
      · exact g
      · omega
  · rw [if_neg hfit]
    have hfit2 : s.get_route_load r + I.demand customer ≤ I.vehicle_capacity := by omega
    obtain ⟨t, ht⟩ := exists_rotated_cons h0
    have hrep := RouteRep_isRotated ht (hR.routes r)
    obtain ⟨c0, c1, c2⟩ := chain_of_routeRep hrep
    have hlen := length_le_of_range hrep.nodup hrep.range
    simp only [List.length_cons] at hlen
    have hr0 : r ≠ 0 := by
      have := (hR.bound r (List.ne_nil_of_mem h0)).1
      omega
    have hmem : ∀ w, w ≠ 0 → (w ∈ t ↔ s.get_route_index w = r) := by
      intro w hw
      have := (hR.routes r).mem_iff w hw
      rw [ht.mem_iff] at this
      simp only [List.mem_cons, hw, false_or] at this
      rw [this]
      unfold Solution.get_route_index
      exact ⟨fun g => g.1, fun g => ⟨g, hr0⟩⟩
    have hdep := scan_cost_depot hR customer h0
    cases t with
    | nil =>
      have e : s.get_first_customer r = 0 := c1 rfl
      rw [e]
      obtain ⟨f, rfl⟩ : ∃ f, fuel = f + 1 := ⟨fuel - 1, by omega⟩
      simp only [scan_customers, if_true]
      have h1 := hb.improve_ok r 0 hdep.symm
      refine ⟨_, rfl, h1.same_seen (fun r2 w2 => ?_)⟩
      constructor
      · rintro (g | ⟨g1, g2⟩)
        · exact Or.inl g
        · exact Or.inr ⟨g1, hfit2, Or.inl g2⟩
      · rintro (g | ⟨g1, _, g2 | g2⟩)
        · exact Or.inl g
        · exact Or.inr ⟨g1, g2⟩
        · by_cases e0 : w2 = 0
          · exact Or.inr ⟨g1, e0⟩
          · have := (hmem w2 e0).2 g2
            cases this
    | cons x t2 =>
      obtain ⟨e1, e2⟩ := c2 x t2 rfl
      have e : s.get_first_customer r = x := e1
      rw [e]
      simp only [List.length_cons] at hlen
      obtain ⟨b1, i1, i2⟩ := scan_customers_chain hR customer r t2 x fuel b Seen (by omega) e2
        (fun u hu => ⟨c0 u hu, ht.mem_iff.2 (List.mem_cons_of_mem _ hu)⟩) hb
      rw [i1]
      simp only
      have h1 := i2.improve_ok r 0 hdep.symm
      refine ⟨_, rfl, h1.same_seen (fun r2 w2 => ?_)⟩
      constructor
      · rintro ((g | ⟨g1, g2⟩) | ⟨g1, g2⟩)
        · exact Or.inl g
        · exact Or.inr ⟨g1, hfit2, Or.inr ((hmem w2 (c0 w2 g2)).1 g2)⟩
        · exact Or.inr ⟨g1, hfit2, Or.inl g2⟩
      · rintro (g | ⟨g1, _, g2 | g2⟩)
        · exact Or.inl (Or.inl g)
        · exact Or.inr ⟨g1, g2⟩
        · by_cases e0 : w2 = 0
          · exact Or.inr ⟨g1, e0⟩
          · exact Or.inl (Or.inr ⟨g1, (hmem w2 e0).2 g2⟩)

end Scan

end RuinAndRecreate
namespace RuinAndRecreate

section Step

variable {I : Instance} {s : Solution} {A : Nat → List Int}

/-- The loop over the candidate routes returns and has tried every position of the routes
that have room for the customer. -/
theorem scan_routes_spec (hR : Rep I s A) (customer : Int) {fuel : Nat}
    (hf : I.vertices_num < fuel) :
    ∀ (rs : List Int) (b : Best) (Seen : Nat → Int → Prop),
      (∀ v ∈ rs, ∃ r : Nat, (r : Int) = v ∧ (0 : Int) ∈ A r) →
      BestOK (insertion_cost I s customer) Seen b →
      ∃ b2, scan_routes I s customer fuel rs b = some b2 ∧
        BestOK (insertion_cost I s customer)
          (fun r2 w2 => Seen r2 w2 ∨ (((r2 : Nat) : Int) ∈ rs ∧
            s.get_route_load r2 + I.demand customer ≤ I.vehicle_capacity ∧
            (w2 = 0 ∨ s.get_route_index w2 = r2))) b2 := by
  intro rs
  induction rs with
  | nil =>
    intro b Seen _ hb
    exact ⟨b, rfl, hb.same_seen (fun r w => by simp)⟩
  | cons v rs ih =>
    intro b Seen hrs hb
    obtain ⟨r, hr1, hr2⟩ := hrs v (List.mem_cons_self _ _)
    have hv : v.toNat = r := by rw [← hr1]; simp
    obtain ⟨b1, i1, i2⟩ := scan_route_spec hR customer hf hr2 hb
    obtain ⟨b2, j1, j2⟩ := ih b1 _ (fun u hu => hrs u (List.mem_cons_of_mem _ hu)) i2
    refine ⟨b2, ?_, j2.same_seen (fun r2 w2 => ?_)⟩
    · simp only [scan_routes, hv, i1]
      exact j1
    · simp only [List.mem_cons]
      constructor
      · rintro ((g | ⟨g1, g2, g3⟩) | ⟨g1, g2, g3⟩)
        · exact Or.inl g
        · subst g1
          exact Or.inr ⟨Or.inl hr1, g2, g3⟩
        · exact Or.inr ⟨Or.inr g1, g2, g3⟩
      · rintro (g | ⟨g1 | g1, g2, g3⟩)
        · exact Or.inl (Or.inl g)
        · have e : r2 = r := by
            have : ((r2 : Nat) : Int) = (r : Int) := by rw [g1, hr1]
            exact_mod_cast this
          exact Or.inl (Or.inr ⟨e, by rw [← e]; exact g2, by rw [← e]; exact g3⟩)
        · exact Or.inr ⟨g1, g2, g3⟩

/-- The search for the best position returns the variables of a cheapest candidate
position, or no position when there is no candidate. -/
theorem search_spec (hR : Rep I s A) (hdep : ∀ r, A r ≠ [] → (0 : Int) ∈ A r)
    (nb : Int → List Int) {routes : SparseIntSet} (hok : routes.OK) (customer : Int)
    {fuel : Nat} (hf : I.vertices_num < fuel) :
    ∃ b, scan_routes I s customer fuel (collect nb s routes customer).get_elements
        ⟨0, -1, none⟩ = some b ∧
      BestOK (insertion_cost I s customer) (Candidate I nb s customer) b := by
  obtain ⟨c1, c2⟩ := collect_spec nb s hok customer
  have hinit : BestOK (insertion_cost I s customer) (fun _ _ => False) ⟨0, -1, none⟩ :=
    ⟨fun _ => ⟨rfl, fun _ _ g => g⟩, fun c g => by cases g⟩
  have hrs : ∀ v ∈ (collect nb s routes customer).get_elements,
      ∃ r : Nat, (r : Int) = v ∧ (0 : Int) ∈ A r := by
    intro v hv
    obtain ⟨n, n1, n2, n3, n4⟩ := (c2 v).1 hv
    refine ⟨s.get_route_index n, n4, hdep _ ?_⟩
    unfold Solution.is_customer_in_solution at n3
    simp only [decide_eq_true_eq] at n3
    have : n ∈ A (s.customers_list n).route_ptr := ((hR.routes _).mem_iff n n2).2 ⟨rfl, n3⟩
    exact List.ne_nil_of_mem this
  obtain ⟨b, b1, b2⟩ := scan_routes_spec hR customer hf _ _ _ hrs hinit
  refine ⟨b, b1, b2.same_seen (fun r w => ?_)⟩
  unfold Candidate Near
  rw [c2]
  constructor
  · rintro (g | ⟨⟨n, n1, n2, n3, n4⟩, g2, g3⟩)
    · exact absurd g id
    · exact ⟨⟨n, n1, n2, n3, by exact_mod_cast n4⟩, g2, g3⟩
  · rintro ⟨⟨n, n1, n2, n3, n4⟩, g2, g3⟩
    exact Or.inr ⟨⟨n, n1, n2, n3, by rw [n4]⟩, g2, g3⟩

end Step

end RuinAndRecreate
namespace RuinAndRecreate

section Place

variable {I : Instance} {fuel : Nat} {s : Solution} {A : Nat → List Int}

/-- A customer that is not served gets a route of its own: the solution stays sound. -/
theorem build_sound (hsym : CostSym I) (hf : I.vertices_num < fuel) (F : Sound I fuel s A)
    {c : Int} (hc0 : 0 < c) (hcN : c < (I.vertices_num : Int)) (hun : ∀ r, c ∉ A r)
    (hcapd : I.demand c ≤ I.vehicle_capacity) :
    ∃ B, Sound I fuel (Solution.build_one_customer_route I s true c).2 B ∧ (∃ r, c ∈ B r) ∧
      ∀ v, v ≠ 0 → v ≠ c → ∀ r, (v ∈ B r ↔ v ∈ A r) := by
  obtain ⟨hR, _⟩ := F.mutated.inv hsym hf
  obtain ⟨hP, hmax⟩ := F.mutated.pool_full hsym hf
  have hcne : c ≠ 0 := by omega
  have hpool := hR.pool_nonempty hP hmax F.full hc0 hcN hun
  have hptr := hR.absent_ptr hcne hun
  have M := Mutated.build true c F.mutated hc0 hcN hptr hpool
  obtain ⟨pa, _, _⟩ := hR.pool_absent _ (le_refl _) hpool
  rw [← Solution.build_route_eq I s true c] at pa
  generalize (Solution.build_one_customer_route I s true c).1 = r1 at M pa
  refine ⟨upd A r1 [0, c], ⟨M, fun r hr => ?_, fun r hr => ?_, fun r => ?_⟩, ⟨r1, ?_⟩,
    fun v hv0 hvc r => ?_⟩
  · by_cases e : r = r1
    · subst e; rw [upd_same]; simp
    · rw [upd_other _ _ _ _ e] at hr ⊢; exact F.depot r hr
  · by_cases e : r = r1
    · subst e; rw [upd_same]; exact ⟨c, by simp, hcne⟩
    · rw [upd_other _ _ _ _ e] at hr ⊢; exact F.full r hr
  · by_cases e : r = r1
    · subst e
      rw [upd_same, loadOf_cons, if_pos rfl, loadOf_cons, if_neg hcne]
      simp only [loadOf_nil]
      omega
    · rw [upd_other _ _ _ _ e]; exact F.cap r
  · rw [upd_same]; simp
  · by_cases e : r = r1
    · subst e
      rw [upd_same, pa]
      simp [hv0, hvc]
    · rw [upd_other _ _ _ _ e]

/-- A customer that is not served is inserted before a vertex of a route that has room
for it: the solution stays sound. -/
theorem insert_sound (hsym : CostSym I) (hf : I.vertices_num < fuel) (F : Sound I fuel s A)
    {c : Int} (hc0 : 0 < c) (hcN : c < (I.vertices_num : Int)) (hun : ∀ r, c ∉ A r)
    {r1 : Nat} {w : Int} (hw : w ∈ A r1)
    (hfit : s.get_route_load r1 + I.demand c ≤ I.vehicle_capacity) :
    ∃ B, Sound I fuel (Solution.insert_vertex_before I s true r1 w c) B ∧ (∃ r, c ∈ B r) ∧
      ∀ v, v ≠ 0 → v ≠ c → ∀ r, (v ∈ B r ↔ v ∈ A r) := by
  obtain ⟨hR, _⟩ := F.mutated.inv hsym hf
  have hcne : c ≠ 0 := by omega
  have hne : A r1 ≠ [] := List.ne_nil_of_mem hw
  obtain ⟨t, ht⟩ := exists_rotated_cons hw
  have hptr := hR.absent_ptr hcne hun
  have hnot : c ∉ upd A r1 (w :: t) r1 := by
    rw [upd_same]
    exact fun g => hun r1 (ht.mem_iff.2 g)
  have M := Mutated.insert true r1 w c t (Mutated.rotate r1 (w :: t) F.mutated ht)
    (upd_same _ _ _) hnot (fun _ => hptr) (le_of_lt hc0) hcN
  rw [upd_upd] at M
  have hload : s.get_route_load r1 = loadOf I (A r1) := (hR.routes r1).load hne
  refine ⟨upd A r1 (c :: w :: t), ⟨M, fun r hr => ?_, fun r hr => ?_, fun r => ?_⟩, ⟨r1, ?_⟩,
    fun v hv0 hvc r => ?_⟩
  · by_cases e : r = r1
    · subst e
      rw [upd_same]
      exact List.mem_cons_of_mem _ (ht.mem_iff.1 (F.depot r hne))
    · rw [upd_other _ _ _ _ e] at hr ⊢; exact F.depot r hr
  · by_cases e : r = r1
    · subst e; rw [upd_same]; exact ⟨c, by simp, hcne⟩
    · rw [upd_other _ _ _ _ e] at hr ⊢; exact F.full r hr
  · by_cases e : r = r1
    · subst e
      rw [upd_same, loadOf_cons, if_neg hcne, ← loadOf_perm I ht.perm, ← hload]
      omega
    · rw [upd_other _ _ _ _ e]; exact F.cap r
  · rw [upd_same]; simp
  · by_cases e : r = r1
    · subst e
      rw [upd_same, ht.mem_iff]
      simp [hvc]
    · rw [upd_other _ _ _ _ e]

theorem recreate_step_eq (I : Instance) (nb : Int → List Int) (fuel : Nat) (s : Solution)
    (routes : SparseIntSet) (customer : Int) {b : Best}
    (hb : scan_routes I s customer fuel (collect nb s routes customer).get_elements
      ⟨0, -1, none⟩ = some b) :
    recreate_step I nb fuel s routes customer =
      some (if b.route = 0 ∨ below (2 * I.cost customer 0) b.cost = true then
          (Solution.build_one_customer_route I s true customer).2
        else Solution.insert_vertex_before I s true b.route b.wh customer,
        collect nb s routes customer) := by
  unfold recreate_step
  rw [hb]
  simp only
  have e : s.get_end_route = 0 := rfl
  rw [e]
  split_ifs <;> rfl

theorem Candidate.mem (hR : Rep I s A) (hdep : ∀ r, A r ≠ [] → (0 : Int) ∈ A r)
    {nb : Int → List Int} {customer : Int} {r : Nat} {w : Int}
    (h : Candidate I nb s customer r w) : r ≠ 0 ∧ w ∈ A r := by
  obtain ⟨⟨n, n1, n2, n3, n4⟩, _, h3⟩ := h
  unfold Solution.is_customer_in_solution at n3
  simp only [decide_eq_true_eq] at n3
  have hn : n ∈ A (s.customers_list n).route_ptr := ((hR.routes _).mem_iff n n2).2 ⟨rfl, n3⟩
  have e : (s.customers_list n).route_ptr = r := n4
  rw [e] at hn n3
  refine ⟨n3, ?_⟩
  by_cases e0 : w = 0
  · rw [e0]
    exact hdep r (List.ne_nil_of_mem hn)
  · rcases h3 with g | g
    · exact absurd g e0
    · exact ((hR.routes r).mem_iff w e0).2 ⟨g, n3⟩

/-- One step of the recreate phase: it returns, the customer is served again, the solution
stays sound, and the position is chosen as the specification says. -/
theorem recreate_step_spec (hsym : CostSym I) (hf : I.vertices_num < fuel)
    (F : Sound I fuel s A) (nb : Int → List Int) {routes : SparseIntSet} (hok : routes.OK)
    {c : Int} (hc0 : 0 < c) (hcN : c < (I.vertices_num : Int)) (hun : ∀ r, c ∉ A r)
    (hcapd : I.demand c ≤ I.vehicle_capacity) :
    ∃ out B, recreate_step I nb fuel s routes c = some out ∧ Sound I fuel out.1 B ∧ out.2.OK ∧
      (∃ r, c ∈ B r) ∧ (∀ v, v ≠ 0 → v ≠ c → ∀ r, (v ∈ B r ↔ v ∈ A r)) ∧
      Placed I nb fuel s routes c := by
  obtain ⟨hR, _⟩ := F.mutated.inv hsym hf
  obtain ⟨b, hb1, hb2, hb3⟩ := search_spec hR F.depot nb hok c hf
  have hstep := recreate_step_eq I nb fuel s routes c hb1
  obtain ⟨k1, _⟩ := collect_spec nb s hok c
  have hbuild := build_sound hsym hf F hc0 hcN hun hcapd
  cases hcost : b.cost with
  | none =>
    obtain ⟨e0, enone⟩ := hb2 hcost
    rw [if_pos (Or.inl e0)] at hstep
    obtain ⟨B, b1, b2, b3⟩ := hbuild
    refine ⟨_, B, hstep, b1, k1, b2, b3, Or.inr ⟨Or.inl enone, ?_⟩⟩
    rw [hstep]
    rfl
  | some c0 =>
    obtain ⟨s1, s2, s3⟩ := hb3 c0 hcost
    obtain ⟨m1, m2⟩ := s1.mem hR F.depot
    have hcheap : Cheapest I nb s c b.route b.wh :=
      ⟨s1, fun r w g => by rw [s2]; exact s3 r w g⟩
    by_cases h2 : 2 * I.cost c 0 < c0
    · have e : below (2 * I.cost c 0) b.cost = true := by rw [hcost]; simp [below, h2]
      rw [if_pos (Or.inr e)] at hstep
      obtain ⟨B, b1, b2, b3⟩ := hbuild
      refine ⟨_, B, hstep, b1, k1, b2, b3, Or.inr ⟨Or.inr ⟨b.route, b.wh, hcheap, ?_⟩, ?_⟩⟩
      · rw [s2]; exact h2
      · rw [hstep]
        rfl
    · have e : ¬ (b.route = 0 ∨ below (2 * I.cost c 0) b.cost = true) := by
        rw [hcost]
        simp [below, h2, m1]
      rw [if_neg e] at hstep
      obtain ⟨B, b1, b2, b3⟩ := insert_sound hsym hf F hc0 hcN hun m2 s1.2.1
      refine ⟨_, B, hstep, b1, k1, b2, b3, Or.inl ⟨b.route, b.wh, hcheap, ?_, ?_⟩⟩
      · rw [s2]; exact h2
      · rw [hstep]
        rfl

end Place

end RuinAndRecreate
namespace RuinAndRecreate

/-- The recreate loop returns, serves every customer of its list again, keeps the solution
sound, and places every customer as the specification says. -/
theorem recreate_sound {I : Instance} {fuel : Nat} (hsym : CostSym I)
    (hf : I.vertices_num < fuel)
    (hcapd : ∀ c, 0 < c → c < (I.vertices_num : Int) → I.demand c ≤ I.vehicle_capacity)
    (nb : Int → List Int) :
    ∀ (l : List Int) (s : Solution) (A : Nat → List Int) (routes : SparseIntSet),
    Sound I fuel s A → routes.OK → l.Nodup →
    (∀ c ∈ l, 0 < c ∧ c < (I.vertices_num : Int) ∧ ∀ r, c ∉ A r) →
    ∃ out B, recreate I nb fuel l s routes = some out ∧ Sound I fuel out.1 B ∧ out.2.OK ∧
      (∀ c ∈ l, ∃ r, c ∈ B r) ∧ (∀ v, v ≠ 0 → v ∉ l → ∀ r, (v ∈ B r ↔ v ∈ A r)) ∧
      (∀ pre c post, l = pre ++ c :: post →
        ∃ sp, recreate I nb fuel pre s routes = some sp ∧ Placed I nb fuel sp.1 sp.2 c) := by
  intro l
  induction l with
  | nil =>
    intro s A routes F hok _ _
    refine ⟨(s, routes), A, rfl, F, hok, fun c hc => (by cases hc), fun v _ _ r => Iff.rfl,
      fun pre c post h => ?_⟩
    have := congrArg List.length h
    simp at this
    omega
  | cons c rest ih =>
    intro s A routes F hok hnd hl
    obtain ⟨q1, q2, q3⟩ := hl c (List.mem_cons_self _ _)
    obtain ⟨out1, B1, s1, s2, s3, s4, s5, s6⟩ :=
      recreate_step_spec hsym hf F nb hok q1 q2 q3 (hcapd c q1 q2)
    have hnd2 := List.nodup_cons.1 hnd
    have hl2 : ∀ c2 ∈ rest, 0 < c2 ∧ c2 < (I.vertices_num : Int) ∧ ∀ r, c2 ∉ B1 r := by
      intro c2 hc2
      obtain ⟨d1, d2, d3⟩ := hl c2 (List.mem_cons_of_mem _ hc2)
      refine ⟨d1, d2, fun r hm => d3 r ((s5 c2 (by omega) (fun e => hnd2.1 (e ▸ hc2)) r).1 hm)⟩
    obtain ⟨out, B, i1, i2, i3, i4, i5, i6⟩ := ih out1.1 B1 out1.2 s2 s3 hnd2.2 hl2
    have hrec : recreate I nb fuel (c :: rest) s routes = recreate I nb fuel rest out1.1 out1.2 := by
      simp only [recreate, s1]
    refine ⟨out, B, by rw [hrec]; exact i1, i2, i3, fun c2 hc2 => ?_, fun v hv0 hv r => ?_,
      fun pre c2 post h => ?_⟩
    · rcases List.mem_cons.1 hc2 with e | e
      · subst e
        obtain ⟨r, hr⟩ := s4
        exact ⟨r, (i5 c2 (by omega) hnd2.1 r).2 hr⟩
      · exact i4 c2 e
    · simp only [List.mem_cons, not_or] at hv
      exact (i5 v hv0 hv.2 r).trans (s5 v hv0 hv.1 r)
    · cases pre with
      | nil =>
        simp only [List.nil_append, List.cons.injEq] at h
        obtain ⟨h1, _⟩ := h
        subst h1
        exact ⟨(s, routes), rfl, s6⟩
      | cons x pre2 =>
        simp only [List.cons_append, List.cons.injEq] at h
        obtain ⟨h1, h2⟩ := h
        subst h1
        obtain ⟨sp, p1, p2⟩ := i6 pre2 c2 post h2
        refine ⟨sp, ?_, p2⟩
        simp only [recreate, s1]
        exact p1

end RuinAndRecreate
/-! ## The open-addressing tables -/

theorem next2pow_rows : next2pow ((2 * 25 + 3) * 5 / 4) = 2 ^ 7 ∧ next2pow (3 * 25 * 5 / 4) = 2 ^ 7 ∧
    SmallFlatMap.realSize = 2 ^ 5 := by
  refine ⟨by decide, by decide, by decide⟩

theorem to_unsigned_of_range {v : Int} (h0 : 0 ≤ v) (h1 : v < 2147483647) :
    to_unsigned v = v.toNat ∧ to_unsigned v ≠ SmallFlatSet.emptyValue := by
  have e : to_unsigned v = v.toNat := by
    unfold to_unsigned
    rw [Int.emod_eq_of_lt h0 (by omega)]
  refine ⟨e, ?_⟩
  rw [e]
  unfold SmallFlatSet.emptyValue
  omega

theorem to_unsigned_inj {u v : Int} (hu : 0 ≤ u ∧ u < 2147483647) (hv : 0 ≤ v ∧ v < 2147483647)
    (h : to_unsigned u = to_unsigned v) : u = v := by
  rw [(to_unsigned_of_range hu.1 hu.2).1, (to_unsigned_of_range hv.1 hv.2).1] at h
  omega

/-- The loop of `find` stops at the first slot, counted from the home slot, that holds the
value or is empty. -/
theorem probe_run (keys : Nat → Nat) (e v k : Nat) : ∀ (fuel c d : Nat), c ≤ d → d < c + fuel →
    (keys ((v + d) % 2 ^ k) = v ∨ keys ((v + d) % 2 ^ k) = e) →
    ∃ d2, c ≤ d2 ∧ d2 ≤ d ∧ probe keys e (2 ^ k) v fuel ((v + c) % 2 ^ k) = some ((v + d2) % 2 ^ k) ∧
      (keys ((v + d2) % 2 ^ k) = v ∨ keys ((v + d2) % 2 ^ k) = e) ∧
      ∀ c2, c ≤ c2 → c2 < d2 → keys ((v + c2) % 2 ^ k) ≠ v ∧ keys ((v + c2) % 2 ^ k) ≠ e := by
  intro fuel
  induction fuel with
  | zero => intro c d h1 h2; omega
  | succ f ih =>
    intro c d h1 h2 h3
    by_cases g : keys ((v + c) % 2 ^ k) ≠ v ∧ keys ((v + c) % 2 ^ k) ≠ e
    · have hcd : c ≠ d := by
        rintro rfl
        rcases h3 with h3 | h3
        · exact g.1 h3
        · exact g.2 h3
      obtain ⟨d2, a1, a2, a3, a4, a5⟩ := ih (c + 1) d (by omega) (by omega) h3
      refine ⟨d2, by omega, a2, ?_, a4, ?_⟩
      · unfold probe
        rw [if_pos g, Nat.and_pow_two_sub_one_eq_mod, Nat.mod_add_mod]
        exact a3
      · intro c2 hc2 hc3
        by_cases e2 : c2 = c
        · subst e2; exact g
        · exact a5 c2 (by omega) hc3
    · refine ⟨c, le_refl _, h1, ?_, ?_, fun c2 hc2 hc3 => by omega⟩
      · unfold probe
        rw [if_neg g]
      · by_contra g2
        push_neg at g2
        exact g ⟨g2.1, g2.2⟩

/-- A table with fewer values than slots has an empty slot. -/
theorem TableOK.exists_empty {keys : Nat → Nat} {e M : Nat} {S : Finset Nat}
    (h : TableOK keys e M S) (hs : S.card < M) : ∃ p, p < M ∧ keys p = e := by
  by_contra hne
  push_neg at hne
  have hmap : ∀ a ∈ Finset.range M, keys a ∈ S := by
    intro a ha
    have ha2 := Finset.mem_range.1 ha
    rcases h.slots a ha2 with g | g
    · exact absurd g (hne a ha2)
    · exact g
  have hinj : Set.InjOn keys (Finset.range M : Finset Nat) := by
    intro a ha b hb hab
    have ha2 : a < M := Finset.mem_range.1 ha
    have hb2 : b < M := Finset.mem_range.1 hb
    exact h.inj a b ha2 hb2 hab (hne a ha2)
  have := Finset.card_le_card_of_injOn keys hmap hinj
  rw [Finset.card_range] at this
  omega

/-- Method `find` on a table that is not full: the slot returned holds the value when the
table holds it, and is the first empty slot of the probe sequence otherwise. -/
theorem TableOK.find_spec {keys : Nat → Nat} {e k : Nat} {S : Finset Nat}
    (h : TableOK keys e (2 ^ k) S) (hs : S.card < 2 ^ k) (v : Nat) (hv : v ≠ e) :
    ∃ d, d < 2 ^ k ∧ probe keys e (2 ^ k) v (2 ^ k) (v &&& (2 ^ k - 1)) = some ((v + d) % 2 ^ k) ∧
      (v ∈ S → keys ((v + d) % 2 ^ k) = v) ∧ (v ∉ S → keys ((v + d) % 2 ^ k) = e) ∧
      ∀ c, c < d → keys ((v + c) % 2 ^ k) ≠ e := by
  have hpos : 0 < 2 ^ k := Nat.two_pow_pos k
  have hex : ∃ d0, d0 < 2 ^ k ∧ (keys ((v + d0) % 2 ^ k) = v ∨ keys ((v + d0) % 2 ^ k) = e) := by
    by_cases hvS : v ∈ S
    · obtain ⟨d, d1, d2, _⟩ := h.reach v hvS
      exact ⟨d, d1, Or.inl d2⟩
    · obtain ⟨p, p1, p2⟩ := h.exists_empty hs
      refine ⟨(p + (2 ^ k - v % 2 ^ k)) % 2 ^ k, Nat.mod_lt _ hpos, Or.inr ?_⟩
      have hvm : v % 2 ^ k < 2 ^ k := Nat.mod_lt _ hpos
      have : (v + (p + (2 ^ k - v % 2 ^ k)) % 2 ^ k) % 2 ^ k = p := by
        rw [Nat.add_mod_mod, Nat.add_mod]
        have e1 : v % 2 ^ k + (p + (2 ^ k - v % 2 ^ k)) % 2 ^ k =
            v % 2 ^ k + (p + (2 ^ k - v % 2 ^ k)) % 2 ^ k := rfl
        have e2 : (v % 2 ^ k + (p + (2 ^ k - v % 2 ^ k)) % 2 ^ k) % 2 ^ k =
            (v % 2 ^ k + (p + (2 ^ k - v % 2 ^ k))) % 2 ^ k := Nat.add_mod_mod _ _ _
        rw [e2]
        have e3 : v % 2 ^ k + (p + (2 ^ k - v % 2 ^ k)) = p + 2 ^ k := by omega
        rw [e3, Nat.add_mod_right, Nat.mod_eq_of_lt p1]
      rw [this]
      exact p2
  obtain ⟨d0, d01, d02⟩ := hex
  obtain ⟨d2, _, a2, a3, a4, a5⟩ := probe_run keys e v k (2 ^ k) 0 d0 (Nat.zero_le _) (by omega) d02
  rw [Nat.add_zero, ← Nat.and_pow_two_sub_one_eq_mod] at a3
  have hne : ∀ c, c < d2 → keys ((v + c) % 2 ^ k) ≠ e := fun c hc => (a5 c (Nat.zero_le _) hc).2
  refine ⟨d2, by omega, a3, ?_, ?_, hne⟩
  · intro hvS
    rcases a4 with g | g
    · exact g
    · exfalso
      obtain ⟨d, d1, d3, d4⟩ := h.reach v hvS
      rcases Nat.lt_trichotomy d2 d with c | c | c
      · exact d4 d2 c g
      · subst c
        exact hv (d3.symm.trans g)
      · exact (a5 d (Nat.zero_le _) c).1 d3
  · intro hvS
    rcases a4 with g | g
    · exfalso
      rcases h.slots _ (Nat.mod_lt (v + d2) hpos) with g2 | g2
      · exact hv (g.symm.trans g2)
      · rw [g] at g2
        exact hvS g2
    · exact g

/-- Writing a new value into the empty slot that `find` returns. -/
theorem TableOK.insert_table {keys : Nat → Nat} {e k : Nat} {S : Finset Nat}
    (h : TableOK keys e (2 ^ k) S) {v d : Nat} (hv : v ≠ e) (hvS : v ∉ S) (hd : d < 2 ^ k)
    (hp : keys ((v + d) % 2 ^ k) = e) (hfull : ∀ c, c < d → keys ((v + c) % 2 ^ k) ≠ e) :
    TableOK (upd keys ((v + d) % 2 ^ k) v) e (2 ^ k) (insert v S) := by
  have hpos : 0 < 2 ^ k := Nat.two_pow_pos k
  refine ⟨fun p hp2 => ?_, fun p q hp2 hq2 hpq hpe => ?_, fun w hw => ?_, ?_⟩
  · by_cases g : p = (v + d) % 2 ^ k
    · right
      rw [g, upd_same]
      exact Finset.mem_insert_self _ _
    · rw [upd_other _ _ _ _ g]
      rcases h.slots p hp2 with g2 | g2
      · exact Or.inl g2
      · exact Or.inr (Finset.mem_insert_of_mem g2)
  · have key : ∀ a, a < 2 ^ k → a ≠ (v + d) % 2 ^ k → keys a ≠ e → keys a ≠ v := by
      intro a ha _ hae hav
      rcases h.slots a ha with g | g
      · exact hae g
      · rw [hav] at g
        exact hvS g
    by_cases g1 : p = (v + d) % 2 ^ k <;> by_cases g2 : q = (v + d) % 2 ^ k
    · rw [g1, g2]
    · exfalso
      rw [g1, upd_same, upd_other _ _ _ _ g2] at hpq
      have hqe : keys q ≠ e := by rw [← hpq]; exact hv
      exact key q hq2 g2 hqe hpq.symm
    · exfalso
      rw [g2, upd_same, upd_other _ _ _ _ g1] at hpq
      rw [upd_other _ _ _ _ g1] at hpe
      exact key p hp2 g1 hpe hpq
    · rw [upd_other _ _ _ _ g1, upd_other _ _ _ _ g2] at hpq
      rw [upd_other _ _ _ _ g1] at hpe
      exact h.inj p q hp2 hq2 hpq hpe
  · rcases Finset.mem_insert.1 hw with rfl | hw
    · refine ⟨d, hd, upd_same _ _ _, fun c hc => ?_⟩
      have hc2 := hfull c hc
      have hne : (w + c) % 2 ^ k ≠ (w + d) % 2 ^ k := by
        intro e2
        rw [e2] at hc2
        exact hc2 hp
      rw [upd_other _ _ _ _ hne]
      exact hc2
    · obtain ⟨d1, a1, a2, a3⟩ := h.reach w hw
      have hwe : w ≠ e := fun e2 => h.ne (e2 ▸ hw)
      have hne1 : (w + d1) % 2 ^ k ≠ (v + d) % 2 ^ k := by
        intro e2
        rw [e2, hp] at a2
        exact hwe a2.symm
      refine ⟨d1, a1, by rw [upd_other _ _ _ _ hne1]; exact a2, fun c hc => ?_⟩
      have hc2 := a3 c hc
      have hne : (w + c) % 2 ^ k ≠ (v + d) % 2 ^ k := by
        intro e2
        rw [e2] at hc2
        exact hc2 hp
      rw [upd_other _ _ _ _ hne]
      exact hc2
  · intro he
    rcases Finset.mem_insert.1 he with g | g
    · exact hv g.symm
    · exact h.ne g

theorem TableOK.of_empty (e M : Nat) : TableOK (fun _ => e) e M ∅ :=
  ⟨fun _ _ => Or.inl rfl, fun _ _ _ _ _ h => absurd rfl h, fun v hv => absurd hv (Finset.not_mem_empty v),
    Finset.not_mem_empty e⟩

/-! ## Rows of the bit matrix and the map of route loads -/

theorem mem_unsigned_iff {S : List Int} (hS : ∀ u ∈ S, 0 ≤ u ∧ u < 2147483647) {v : Int}
    (hv : 0 ≤ v ∧ v < 2147483647) : to_unsigned v ∈ (S.map to_unsigned).toFinset ↔ v ∈ S := by
  rw [List.mem_toFinset, List.mem_map]
  constructor
  · rintro ⟨u, hu, e⟩
    rw [← to_unsigned_inj (hS u hu) hv e]
    exact hu
  · exact fun h => ⟨v, h, rfl⟩

theorem unsigned_card_lt {S : List Int} {n : Nat} (h : S.length < n) :
    (S.map to_unsigned).toFinset.card < n := by
  have := List.toFinset_card_le (S.map to_unsigned)
  rw [List.length_map] at this
  omega

namespace BitMatrix

theorem RowOK.same_row {m m2 : BitMatrix} {row : Nat} {S : List Int} (h : m.RowOK row S)
    (e : m2.data row = m.data row) (e2 : m2.realSize = m.realSize) : m2.RowOK row S :=
  ⟨by rw [e, e2]; exact h.table, h.range⟩

theorem reset_row (m : BitMatrix) (row : Nat) :
    (m.reset row).RowOK row [] ∧ (m.reset row).realSize = m.realSize ∧
    ∀ r, r ≠ row → (m.reset row).data r = m.data r := by
  refine ⟨⟨?_, fun v hv => absurd hv (List.not_mem_nil v)⟩, rfl, fun r hr => upd_other _ _ _ _ hr⟩
  show TableOK (upd m.data row SmallFlatSet.clear row) _ _ _
  rw [upd_same]
  exact TableOK.of_empty _ _

theorem overwrite_ok (m : BitMatrix) {src dst : Nat} {S : List Int} (h : m.RowOK src S) :
    (m.overwrite src dst).RowOK dst S ∧ (m.overwrite src dst).realSize = m.realSize ∧
    ∀ r, r ≠ dst → (m.overwrite src dst).data r = m.data r := by
  refine ⟨⟨?_, h.range⟩, rfl, fun r hr => upd_other _ _ _ _ hr⟩
  show TableOK (upd m.data dst (m.data src) dst) _ _ _
  rw [upd_same]
  exact h.table

/-- Method `is_set` on a row that is not full. -/
theorem is_set_ok {m : BitMatrix} {row : Nat} {S : List Int} (hm : m.realSize = 2 ^ 7)
    (h : m.RowOK row S) (hlen : S.length < 128) {v : Int} (hv : 0 ≤ v ∧ v < 2147483647) :
    m.is_set row v = some (decide (v ∈ S)) := by
  have ht := h.table
  rw [hm] at ht
  obtain ⟨d, _, d2, d3, d4, _⟩ := ht.find_spec (unsigned_card_lt hlen) (to_unsigned v)
    (to_unsigned_of_range hv.1 hv.2).2
  unfold is_set SmallFlatSet.count SmallFlatSet.find
  rw [hm, d2]
  dsimp only
  by_cases g : v ∈ S
  · rw [d3 ((mem_unsigned_iff h.range hv).2 g), decide_eq_true g,
      decide_eq_true (to_unsigned_of_range hv.1 hv.2).2]
  · rw [d4 (fun c => g ((mem_unsigned_iff h.range hv).1 c)), decide_eq_false g]
    simp

/-- Method `set` on a row that is not full. -/
theorem set_ok {m : BitMatrix} {row : Nat} {S : List Int} (hm : m.realSize = 2 ^ 7)
    (h : m.RowOK row S) (hlen : S.length < 127) {v : Int} (hv : 0 ≤ v ∧ v < 2147483647) :
    ∃ m2, m.set row v = some m2 ∧ m2.realSize = 2 ^ 7 ∧ m2.RowOK row (v :: S) ∧
      ∀ r, r ≠ row → m2.data r = m.data r := by
  have ht := h.table
  rw [hm] at ht
  have hne := (to_unsigned_of_range hv.1 hv.2).2
  obtain ⟨d, d1, d2, d3, d4, d5⟩ := ht.find_spec (unsigned_card_lt (by omega)) (to_unsigned v) hne
  have hrange : ∀ u ∈ v :: S, 0 ≤ u ∧ u < 2147483647 := by
    intro u hu
    rcases List.mem_cons.1 hu with rfl | hu
    · exact hv
    · exact h.range u hu
  unfold set SmallFlatSet.insert SmallFlatSet.find
  rw [hm, d2]
  dsimp only
  by_cases g : v ∈ S
  · have e := d3 ((mem_unsigned_iff h.range hv).2 g)
    have hif : m.data row ((to_unsigned v + d) % 2 ^ 7) ≠ SmallFlatSet.emptyValue := by
      rw [e]; exact hne
    rw [if_pos hif]
    refine ⟨_, rfl, rfl, ⟨?_, hrange⟩, fun r hr => upd_other _ _ _ _ hr⟩
    show TableOK (upd m.data row (m.data row) row) _ (2 ^ 7) _
    rw [upd_same, List.map_cons, List.toFinset_cons,
      Finset.insert_eq_of_mem ((mem_unsigned_iff h.range hv).2 g)]
    exact ht
  · have hnot : to_unsigned v ∉ (S.map to_unsigned).toFinset :=
      fun c => g ((mem_unsigned_iff h.range hv).1 c)
    have e := d4 hnot
    rw [if_neg (by rw [e]; exact fun c => c rfl)]
    refine ⟨_, rfl, rfl, ⟨?_, hrange⟩, fun r hr => upd_other _ _ _ _ hr⟩
    show TableOK (upd m.data row (upd (m.data row) _ _) row) _ (2 ^ 7) _
    rw [upd_same, List.map_cons, List.toFinset_cons]
    exact ht.insert_table hne hnot d1 e d5

end BitMatrix

namespace SmallFlatMap

theorem clear_ok (buffer : Nat → Nat × Int) (f : Nat → Int) : MapOK (clear buffer) ∅ f :=
  ⟨TableOK.of_empty _ _, fun p _ h => absurd rfl h⟩

/-- Method `find` on a map that is not full. -/
theorem MapOK.find_ok {buffer : Nat → Nat × Int} {K : Finset Nat} {f : Nat → Int}
    (h : MapOK buffer K f) (hK : K.card < 32) {k : Nat} (hk : k ≠ 0) :
    ∃ p, find buffer k = some p ∧ p < 32 ∧ (k ∈ K → (buffer p).1 = k ∧ (buffer p).2 = f k) ∧
      (k ∉ K → (buffer p).1 = 0) := by
  have ht := h.table
  rw [next2pow_rows.2.2] at ht
  obtain ⟨d, _, d2, d3, d4, _⟩ := ht.find_spec (by simpa using hK) k hk
  have hlt : (k + d) % 2 ^ 5 < 32 := Nat.mod_lt _ (by decide)
  refine ⟨_, ?_, hlt, fun g => ?_, fun g => d4 g⟩
  · unfold find
    rw [next2pow_rows.2.2]
    exact d2
  · have e := d3 g
    refine ⟨e, ?_⟩
    have := h.vals _ (by rw [next2pow_rows.2.2]; exact hlt) (by rw [e]; exact hk)
    rw [this, e]

/-- Read of a key of the map through `operator[]`: the map is not changed. -/
theorem MapOK.read_ok {buffer : Nat → Nat × Int} {K : Finset Nat} {f : Nat → Int}
    (h : MapOK buffer K f) (hK : K.card < 32) {k : Nat} (hk : k ≠ 0) (hin : k ∈ K) :
    read buffer k = some (f k, buffer) := by
  obtain ⟨p, p1, _, p3, _⟩ := h.find_ok hK hk
  obtain ⟨a1, a2⟩ := p3 hin
  unfold read
  rw [p1]
  dsimp only
  rw [a2]
  congr 2
  funext q
  by_cases g : q = p
  · rw [g, upd_same]
    exact Prod.ext a1.symm a2.symm
  · rw [upd_other _ _ _ _ g]

/-- Assignment to a key through `operator[]` on a map that is not full. -/
theorem MapOK.assign_ok {buffer : Nat → Nat × Int} {K : Finset Nat} {f : Nat → Int}
    (h : MapOK buffer K f) (hK : K.card < 31) {k : Nat} (hk : k ≠ 0) (v : Int) :
    ∃ b2, assign buffer k v = some b2 ∧ MapOK b2 (insert k K) (upd f k v) := by
  have ht := h.table
  rw [next2pow_rows.2.2] at ht
  obtain ⟨d, d1, d2, d3, d4, d5⟩ := ht.find_spec (by simpa using (by omega : K.card < 32)) k hk
  have hlt : (k + d) % 2 ^ 5 < 2 ^ 5 := Nat.mod_lt _ (by decide)
  have hfind : find buffer k = some ((k + d) % 2 ^ 5) := by
    unfold find
    rw [next2pow_rows.2.2]
    exact d2
  unfold assign
  rw [hfind]
  refine ⟨_, rfl, ?_, ?_⟩
  · rw [next2pow_rows.2.2]
    by_cases g : k ∈ K
    · have e : (buffer ((k + d) % 2 ^ 5)).1 = k := d3 g
      have hk2 : (fun p => (upd buffer ((k + d) % 2 ^ 5) (k, v) p).1) = fun p => (buffer p).1 := by
        funext q
        by_cases c : q = (k + d) % 2 ^ 5
        · rw [c, upd_same, e]
        · rw [upd_other _ _ _ _ c]
      rw [hk2, Finset.insert_eq_of_mem g]
      exact ht
    · have e : (buffer ((k + d) % 2 ^ 5)).1 = 0 := d4 g
      have hk2 : (fun p => (upd buffer ((k + d) % 2 ^ 5) (k, v) p).1) =
          upd (fun p => (buffer p).1) ((k + d) % 2 ^ 5) k := by
        funext q
        by_cases c : q = (k + d) % 2 ^ 5
        · rw [c, upd_same, upd_same]
        · rw [upd_other _ _ _ _ c, upd_other _ _ _ _ c]
      rw [hk2]
      exact ht.insert_table hk g d1 e d5
  · intro p hp hne
    rw [next2pow_rows.2.2] at hp
    by_cases c : p = (k + d) % 2 ^ 5
    · rw [c, upd_same, upd_same]
    · rw [upd_other _ _ _ _ c] at hne ⊢
      have hv := h.vals p (by rw [next2pow_rows.2.2]; exact hp) hne
      rw [hv]
      have hkk : (buffer p).1 ≠ k := by
        intro e2
        by_cases g : k ∈ K
        · have e : (buffer ((k + d) % 2 ^ 5)).1 = k := d3 g
          exact c (ht.inj p _ hp hlt (e2.trans e.symm) hne)
        · rcases ht.slots p hp with g2 | g2
          · exact hne g2
          · exact g (e2 ▸ g2)
      rw [upd_other _ _ _ _ hkk]

end SmallFlatMap

/-! ## What a relocation writes -/

namespace MGHeap

/-- Method `reset` on a heap whose order may be broken. -/
theorem reset_linked (st : MGHeap) (h : st.Linked) :
    st.reset.OK ∧ st.reset.size = 0 ∧ (∀ m, st.reset.heap_index m = -1) ∧
      st.reset.delta = st.delta := by
  obtain ⟨_, _, a3, a4⟩ := reset_loop_spec st st.size
  have hall : ∀ m, st.reset.heap_index m = -1 := by
    intro m
    show (st.reset_loop st.size).heap_index m = -1
    rw [a4 m]
    by_cases c : ∃ j, j < st.size ∧ st.heap j = m
    · rw [if_pos c]
    · rw [if_neg c]
      exact h.out m (fun k hk e => c ⟨k, hk, e⟩)
  exact ⟨⟨⟨(fun a b ha => by cases ha), (fun n hn => by cases hn), (fun m _ => hall m)⟩,
    (fun k _ hk => by cases hk)⟩, rfl, hall, a3⟩

theorem set_delta_linked (st : MGHeap) (m : Nat) (v : Int) (h : st.Linked) :
    (st.set_delta m v).Linked := ⟨h.inj, h.idx, h.out⟩

end MGHeap

namespace Solution

section Frames

variable (I : Instance) (s : Solution) (ra : Bool) (r : Nat)

theorem remove_vertex_prev_field {v : Int} (hv : v ≠ 0) (u : Int) (hu : u ≠ v)
    (hn : u ≠ (s.customers_list v).next) :
    ((remove_vertex I s ra r v).1.customers_list u).prev = (s.customers_list u).prev ∧
    ((remove_vertex I s ra r v).1.customers_list u).c_prev_curr =
      (s.customers_list u).c_prev_curr := by
  simp only [remove_vertex, hv, if_false]
  constructor
  · simp [reset_vertex, set_prev_vertex_ptr, set_next_vertex_ptr, set_cost_prev_vertex, hu, hn]
  · simp [reset_vertex, set_prev_vertex_ptr, set_next_vertex_ptr, set_cost_prev_vertex, hu, hn]

theorem remove_vertex_next_field {v : Int} (hv : v ≠ 0) (u : Int) (hu : u ≠ v)
    (hp : u ≠ (s.customers_list v).prev) :
    ((remove_vertex I s ra r v).1.customers_list u).next = (s.customers_list u).next := by
  simp only [remove_vertex, hv, if_false]
  simp [reset_vertex, set_prev_vertex_ptr, set_next_vertex_ptr, set_cost_prev_vertex, hu, hp]

theorem insert_vertex_prev_field {v w : Int} (hv : v ≠ 0) (u : Int) (hu : u ≠ v) (hw : u ≠ w) :
    ((insert_vertex_before I s ra r w v).customers_list u).prev = (s.customers_list u).prev ∧
    ((insert_vertex_before I s ra r w v).customers_list u).c_prev_curr =
      (s.customers_list u).c_prev_curr := by
  simp only [insert_vertex_before, hv, if_false]
  constructor
  · simp [set_prev_vertex_ptr, set_next_vertex_ptr, set_cost_prev_vertex, get_prev_vertex, hu, hw]
  · simp [set_prev_vertex_ptr, set_next_vertex_ptr, set_cost_prev_vertex, get_prev_vertex, hu, hw]

theorem insert_vertex_next_field {v w : Int} (hv : v ≠ 0) (hw0 : w ≠ 0) (u : Int) (hu : u ≠ v)
    (hq : u ≠ (s.customers_list w).prev) :
    ((insert_vertex_before I s ra r w v).customers_list u).next = (s.customers_list u).next := by
  simp only [insert_vertex_before, hv, if_false]
  simp [set_prev_vertex_ptr, set_next_vertex_ptr, set_cost_prev_vertex, get_prev_vertex, hu, hq, hw0]

theorem remove_vertex_load_other {v : Int} (r2 : Nat) (h : r2 ≠ r) :
    ((remove_vertex I s ra r v).1.routes_list r2).load = (s.routes_list r2).load :=
  (remove_vertex_routes_list I s ra r v r2 h).2.2.1

theorem insert_vertex_load_other {v w : Int} (r2 : Nat) (h : r2 ≠ r) :
    ((insert_vertex_before I s ra r w v).routes_list r2).load = (s.routes_list r2).load :=
  (insert_vertex_routes_list I s ra r w v r2 h).2.2.1

theorem remove_route_load (r2 : Nat) :
    ((s.remove_route ra r).routes_list r2).load = if r2 = r then 0 else (s.routes_list r2).load := by
  by_cases h : r2 = r
  · rw [if_pos h, h]
    exact (remove_route_self s ra r).2.2.2.1
  · rw [if_neg h]
    exact (remove_route_routes_list s ra r r2 h).2.2.1

theorem remove_route_in_solution (r2 : Nat) :
    ((s.remove_route ra r).routes_list r2).in_solution = true →
      (s.routes_list r2).in_solution = true := by
  by_cases h : r2 = r
  · rw [h, (remove_route_self s ra r).1]
    exact fun c => absurd c (by simp)
  · rw [(remove_route_routes_list s ra r r2 h).2.2.2.2.1]
    exact id

end Frames

end Solution

/-! ## One relocation, read through the pointers -/

namespace EjectionChain

section Relocate

variable (I : Instance) (s : Solution) {i j : Int}

theorem fallback_ne {v : Int} (w : Int) (hv : v ≠ 0) :
    s.get_route_index_fallback v w = (s.customers_list v).route_ptr := by
  unfold Solution.get_route_index_fallback
  rw [if_neg hv]

/-- The stored cost after the relocation of customer `i` to before customer `j`. -/
theorem relocate_cost (hi : i ≠ 0) (hj : j ≠ 0) (hij : i ≠ j)
    (hjn : j ≠ (s.customers_list i).next) (hq : (s.customers_list j).prev ≠ i) :
    (relocate I s i j).solution_cost = s.solution_cost +
      (I.cost (s.customers_list i).prev (s.customers_list i).next
        - I.cost (s.customers_list i).prev i - I.cost i (s.customers_list i).next) +
      (I.cost (s.customers_list j).prev i + I.cost i j - (s.customers_list j).c_prev_curr) := by
  have h1 := Solution.remove_vertex_cost I s true (s.customers_list i).route_ptr i
  have hf := Solution.remove_vertex_prev_field I s true (s.customers_list i).route_ptr hi j
    hij.symm hjn
  have hpre : (Solution.remove_vertex I s true (s.customers_list i).route_ptr i).1.InsertPre
      (s.customers_list j).route_ptr j i := by
    refine ⟨hij.symm, ?_, fun c => absurd c hi⟩
    rw [Solution.get_prev_vertex_ne _ _ hj, hf.1]
    exact hq
  have h2 := Solution.insert_vertex_cost I
    (Solution.remove_vertex I s true (s.customers_list i).route_ptr i).1 true
    (s.customers_list j).route_ptr j i hpre
  rw [Solution.get_prev_vertex_ne _ _ hj, Solution.get_cost_prev_vertex_ne _ _ hj, hf.1, hf.2, h1,
    Solution.get_prev_vertex_ne _ _ hi, Solution.get_next_vertex_ne _ _ hi] at h2
  unfold relocate
  rw [fallback_ne s j hi, fallback_ne s i hj]
  dsimp only
  split_ifs
  · rw [(Solution.remove_route_scalars _ true _).1, h2]
  · rw [h2]

/-- The fields of the customers that the relocation of customer `i` to before customer `j`
leaves as they are. -/
theorem relocate_fields (hi : i ≠ 0) (hj : j ≠ 0) (hij : i ≠ j)
    (hjn : j ≠ (s.customers_list i).next) (u : Int) (hu : u ≠ i) :
    ((relocate I s i j).customers_list u).route_ptr = (s.customers_list u).route_ptr ∧
    (u ≠ (s.customers_list i).next → u ≠ j →
      ((relocate I s i j).customers_list u).prev = (s.customers_list u).prev ∧
      ((relocate I s i j).customers_list u).c_prev_curr = (s.customers_list u).c_prev_curr) ∧
    (u ≠ (s.customers_list i).prev → u ≠ (s.customers_list j).prev →
      ((relocate I s i j).customers_list u).next = (s.customers_list u).next) := by
  have hf := Solution.remove_vertex_prev_field I s true (s.customers_list i).route_ptr hi j
    hij.symm hjn
  have hcl : (relocate I s i j).customers_list =
      (Solution.insert_vertex_before I
        (Solution.remove_vertex I s true (s.customers_list i).route_ptr i).1 true
        (s.customers_list j).route_ptr j i).customers_list := by
    unfold relocate
    rw [fallback_ne s j hi, fallback_ne s i hj]
    dsimp only
    split_ifs
    · rw [Solution.remove_route_customers_list]
    · rfl
  rw [hcl]
  refine ⟨?_, fun h1 h2 => ?_, fun h1 h2 => ?_⟩
  · rw [Solution.insert_vertex_route_ptr, if_neg (fun c => hu c.1),
      Solution.remove_vertex_route_ptr, if_neg (fun c => hu c.1)]
  · obtain ⟨a1, a2⟩ := Solution.insert_vertex_prev_field I
      (Solution.remove_vertex I s true (s.customers_list i).route_ptr i).1 true
      (s.customers_list j).route_ptr hi u hu h2
    obtain ⟨b1, b2⟩ := Solution.remove_vertex_prev_field I s true (s.customers_list i).route_ptr hi u
      hu h1
    exact ⟨a1.trans b1, a2.trans b2⟩
  · rw [Solution.insert_vertex_next_field I _ true _ hi hj u hu (by rw [hf.1]; exact h2)]
    exact Solution.remove_vertex_next_field I s true _ hi u hu h1

/-- The stored loads after the relocation of customer `i` to before customer `j`. -/
theorem relocate_load (hi : i ≠ 0) (hj : j ≠ 0) (r : Nat) :
    ((relocate I s i j).routes_list r).load = (s.routes_list r).load +
      (if r = (s.customers_list j).route_ptr then I.demand i else 0) -
      (if r = (s.customers_list i).route_ptr then I.demand i else 0) := by
  have key : ∀ r2, ((Solution.insert_vertex_before I
        (Solution.remove_vertex I s true (s.customers_list i).route_ptr i).1 true
        (s.customers_list j).route_ptr j i).routes_list r2).load = (s.routes_list r2).load +
      (if r2 = (s.customers_list j).route_ptr then I.demand i else 0) -
      (if r2 = (s.customers_list i).route_ptr then I.demand i else 0) := by
    intro r2
    have e1 : ∀ r3, ((Solution.remove_vertex I s true (s.customers_list i).route_ptr i).1.routes_list
        r3).load = (s.routes_list r3).load -
          (if r3 = (s.customers_list i).route_ptr then I.demand i else 0) := by
      intro r3
      by_cases c : r3 = (s.customers_list i).route_ptr
      · rw [if_pos c, c, Solution.remove_vertex_load, if_neg hi]
      · rw [if_neg c, Solution.remove_vertex_load_other I s true _ r3 c]
        ring
    by_cases c : r2 = (s.customers_list j).route_ptr
    · rw [if_pos c, c, Solution.insert_vertex_load, if_neg hi, e1]
      ring
    · rw [if_neg c, Solution.insert_vertex_load_other I _ true _ r2 c, e1]
      ring
  have hsame : ((relocate I s i j).routes_list r).load =
      ((Solution.insert_vertex_before I
        (Solution.remove_vertex I s true (s.customers_list i).route_ptr i).1 true
        (s.customers_list j).route_ptr j i).routes_list r).load := by
    unfold relocate
    rw [fallback_ne s j hi, fallback_ne s i hj]
    dsimp only
    by_cases h1 : (Solution.insert_vertex_before I
        (Solution.remove_vertex I s true (s.customers_list i).route_ptr i).1 true
        (s.customers_list j).route_ptr j i).is_route_empty (s.customers_list i).route_ptr = true
    · rw [if_pos h1, Solution.remove_route_load]
      by_cases g : r = (s.customers_list i).route_ptr
      · rw [if_pos g, g]
        simp only [Solution.is_route_empty, decide_eq_true_eq] at h1
        exact h1.symm
      · rw [if_neg g]
    · rw [if_neg h1]
  rw [hsame, key]

theorem relocate_in_solution (r : Nat)
    (h : ((relocate I s i j).routes_list r).in_solution = true) :
    (s.routes_list r).in_solution = true := by
  unfold relocate at h
  dsimp only at h
  split_ifs at h
  · have := Solution.remove_route_in_solution _ true _ r h
    rwa [Solution.insert_vertex_in_solution, Solution.remove_vertex_in_solution] at this
  · rwa [Solution.insert_vertex_in_solution, Solution.remove_vertex_in_solution] at h

end Relocate

end EjectionChain

/-! ## The relocations of a chain of independent moves -/

namespace EjectionChain

section Run

variable (I : Instance) (mg : MoveGenerators) (s : Solution)

theorem Kept.self (m : Nat) : Kept mg s s m := ⟨⟨rfl, rfl, rfl⟩, ⟨rfl, rfl, rfl⟩⟩

/-- The relocations of a chain of pairwise independent moves change the stored cost by the
sum of the changes read on the solution before the chain, and the stored loads by the
demands moved. -/
theorem run_spec : ∀ (l : List Nat) (t : Solution), (∀ m ∈ l, Proper mg s m) →
    l.Pairwise (Indep mg s) → (∀ m ∈ l, Kept mg s t m) →
    (run I mg l t).solution_cost = t.solution_cost + (l.map (bracket I mg s)).sum ∧
    (∀ r, ((run I mg l t).routes_list r).load =
      (t.routes_list r).load + (l.map (gain I mg s r)).sum) ∧
    (∀ r, ((run I mg l t).routes_list r).in_solution = true →
      (t.routes_list r).in_solution = true) := by
  intro l
  induction l with
  | nil =>
    intro t _ _ _
    exact ⟨by simp [run], fun r => by simp [run], fun r h => h⟩
  | cons a rest ih =>
    intro t hp hpw hk
    obtain ⟨hi, hj, hij, hjn, hq⟩ := hp a (List.mem_cons_self _ _)
    obtain ⟨⟨k1, k2, k3⟩, ⟨k4, k5, k6⟩⟩ := hk a (List.mem_cons_self _ _)
    have hpw2 := List.pairwise_cons.1 hpw
    have hjn2 : (mg.get a).2 ≠ (t.customers_list (mg.get a).1).next := by rw [k2]; exact hjn
    have hq2 : (t.customers_list (mg.get a).2).prev ≠ (mg.get a).1 := by rw [k4]; exact hq
    have hc := relocate_cost I t hi hj hij hjn2 hq2
    have hl := relocate_load I t hi hj
    have hkept : ∀ m ∈ rest, Kept mg s (relocate I t (mg.get a).1 (mg.get a).2) m := by
      intro b hb
      obtain ⟨⟨i1, i2, i3, i4, i5⟩, ⟨j1, j2, j3⟩⟩ := hpw2.1 b hb
      obtain ⟨⟨b1, b2, b3⟩, ⟨b4, b5, b6⟩⟩ := hk b (List.mem_cons_of_mem _ hb)
      obtain ⟨f1, f2, f3⟩ := relocate_fields I t hi hj hij hjn2 (mg.get b).1 i1
      obtain ⟨g1, g2, _⟩ := relocate_fields I t hi hj hij hjn2 (mg.get b).2 j1
      obtain ⟨f4, _⟩ := f2 (by rw [k2]; exact i2) i3
      have f5 := f3 (by rw [k1]; exact i4) (by rw [k4]; exact i5)
      obtain ⟨g3, g4⟩ := g2 (by rw [k2]; exact j2) j3
      exact ⟨⟨f4.trans b1, f5.trans b2, f1.trans b3⟩, ⟨g3.trans b4, g4.trans b5, g1.trans b6⟩⟩
    obtain ⟨r1, r2, r3⟩ := ih (relocate I t (mg.get a).1 (mg.get a).2)
      (fun m hm => hp m (List.mem_cons_of_mem _ hm)) hpw2.2 hkept
    refine ⟨?_, fun r => ?_, fun r h => ?_⟩
    · show (run I mg rest _).solution_cost = _
      rw [r1, hc, List.map_cons, List.sum_cons]
      unfold bracket
      rw [k1, k2, k4, k5]
      ring
    · show ((run I mg rest _).routes_list r).load = _
      rw [r2 r, hl r, List.map_cons, List.sum_cons]
      unfold gain
      rw [k3, k6]
      ring
    · exact relocate_in_solution I t r (r3 r h)

end Run

end EjectionChain

/-! ## A complete solution, read through the pointers -/

section ServedRep

variable {I : Instance} {s : Solution} {A : Nat → List Int}

theorem two_le_length_of_mem {l : List Int} {v : Int} (h0 : (0 : Int) ∈ l) (hv : v ∈ l)
    (hv0 : v ≠ 0) : 2 ≤ l.length := by
  cases l with
  | nil => cases hv
  | cons a t =>
    cases t with
    | nil =>
      simp only [List.mem_singleton] at h0 hv
      exact absurd (hv.trans h0.symm) hv0
    | cons b t2 => simp

/-- A complete solution in which every route has its depot and no route exceeds the
capacity gives the search what it reads. -/
theorem served_of_rep (hR : Rep I s A) (hdep : ∀ r, A r ≠ [] → (0 : Int) ∈ A r)
    (hcomplete : ∀ c : Int, 0 < c → c < (I.vertices_num : Int) → ∃ r, c ∈ A r)
    (hcap : ∀ r, loadOf I (A r) ≤ I.vehicle_capacity) : Served I s := by
  have base : ∀ v : Int, 0 < v → v < (I.vertices_num : Int) → ∃ r, v ∈ A r ∧ A r ≠ [] ∧
      (s.customers_list v).route_ptr = r ∧ r ≠ 0 := by
    intro v h0 h1
    obtain ⟨r, hr⟩ := hcomplete v h0 h1
    obtain ⟨e1, e2⟩ := hR.route_of_mem (by omega) hr
    exact ⟨r, hr, List.ne_nil_of_mem hr, e1, e2⟩
  have facts : ∀ v : Int, 0 < v → v < (I.vertices_num : Int) → ∀ r, v ∈ A r →
      (s.customers_list v).prev ∈ A r ∧ (s.customers_list v).next ∈ A r ∧
      (s.customers_list v).prev ≠ v ∧ (s.customers_list v).next ≠ v ∧
      s.get_next_vertex r (s.customers_list v).prev = v ∧
      s.get_prev_vertex r (s.customers_list v).next = v ∧
      (s.customers_list v).c_prev_curr = I.cost (s.customers_list v).prev v ∧
      s.get_cost_prev_vertex r (s.customers_list v).next = I.cost v (s.customers_list v).next := by
    intro v h0 h1 r hr
    have hv0 : v ≠ 0 := by omega
    have hne : A r ≠ [] := List.ne_nil_of_mem hr
    have hc := (hR.routes r).cycle hne
    have hnx := IsCycle_next_ne hc (hR.routes r).nodup
      (two_le_length_of_mem (hdep r hne) hr hv0)
    obtain ⟨f1, f2, f3, f4, f5⟩ := IsCycle_facts hc v hr
    obtain ⟨g1, g2, g3, g4, g5⟩ := IsCycle_facts hc _ f3
    rw [Solution.get_next_vertex_ne s r hv0] at f1 f3 g5 g1
    rw [Solution.get_prev_vertex_ne s r hv0] at f2 f4 f5
    rw [Solution.get_cost_prev_vertex_ne s r hv0] at f5
    have hn := hnx v hr
    rw [Solution.get_next_vertex_ne s r hv0] at hn
    refine ⟨f4, f3, ?_, hn, f2, f1, f5, ?_⟩
    · intro e
      rw [e] at f2
      exact hnx v hr f2
    · rw [g5, f1]
  refine ⟨fun v h0 h1 => ?_, fun v h0 h1 => ?_, fun v h0 h1 hp => ?_, fun v h0 h1 hn => ?_,
    fun v h0 h1 => ?_, fun v h0 h1 => ?_, fun r hr => ?_⟩
  · obtain ⟨r, hr, hne, e1, e2⟩ := base v h0 h1
    rw [e1]
    exact ⟨e2, ((hR.routes r).present_iff).1 hne⟩
  · obtain ⟨r, hr, hne, e1, e2⟩ := base v h0 h1
    obtain ⟨a1, a2, a3, a4, _⟩ := facts v h0 h1 r hr
    have r1 := (hR.routes r).range _ a1
    have r2 := (hR.routes r).range _ a2
    exact ⟨⟨r1.1, r1.2, a3⟩, ⟨r2.1, r2.2, a4⟩⟩
  · obtain ⟨r, hr, hne, e1, e2⟩ := base v h0 h1
    obtain ⟨a1, _, _, _, a5, _⟩ := facts v h0 h1 r hr
    rw [Solution.get_next_vertex_ne s r hp] at a5
    exact ⟨a5, (hR.route_of_mem hp a1).1.trans e1.symm⟩
  · obtain ⟨r, hr, hne, e1, e2⟩ := base v h0 h1
    obtain ⟨_, a2, _, _, _, a6, _⟩ := facts v h0 h1 r hr
    rw [Solution.get_prev_vertex_ne s r hn] at a6
    exact ⟨a6, (hR.route_of_mem hn a2).1.trans e1.symm⟩
  · obtain ⟨r, hr, hne, e1, e2⟩ := base v h0 h1
    obtain ⟨_, _, _, _, _, _, a7, a8⟩ := facts v h0 h1 r hr
    rw [e1]
    exact ⟨a7, a8⟩
  · obtain ⟨r, hr, hne, e1, e2⟩ := base v h0 h1
    obtain ⟨t, ht⟩ := exists_rotated_cons (hdep r hne)
    have rr := RouteRep_isRotated ht (hR.routes r)
    obtain ⟨c1, _, c3⟩ := chain_of_routeRep rr
    have hvt : v ∈ t := by
      have := ht.mem_iff.1 hr
      rcases List.mem_cons.1 this with e | e
      · omega
      · exact e
    obtain ⟨x, t2, rfl⟩ := List.exists_cons_of_ne_nil (List.ne_nil_of_mem hvt)
    obtain ⟨d1, d2⟩ := c3 x t2 rfl
    have hlen := length_le_of_range rr.nodup rr.range
    simp only [List.length_cons] at hlen
    refine ⟨x, t2, by rw [e1]; exact d1, d2, fun u hu => ?_, by omega⟩
    have hu0 := c1 u hu
    have huA : u ∈ A r := ht.mem_iff.2 (List.mem_cons_of_mem _ hu)
    have hur := (hR.routes r).range u huA
    exact ⟨by omega, hur.2, (hR.route_of_mem hu0 huA).1.trans e1.symm⟩
  · have hne := ((hR.routes r).present_iff).2 hr
    rw [(hR.routes r).load hne]
    exact hcap r

end ServedRep

/-! ## Paths of moves -/

namespace EjectionChain

section PathFacts

variable {I : Instance} {mg : MoveGenerators} {s : Solution}

theorem forb_i_length (l : List Nat) : (forb_i mg s l).length = 2 * l.length := by
  induction l with
  | nil => rfl
  | cons m rest ih => simp only [forb_i, List.length_cons, ih]; omega

theorem forb_j_length (l : List Nat) : (forb_j mg s l).length = 3 * l.length := by
  induction l with
  | nil => rfl
  | cons m rest ih => simp only [forb_j, List.length_cons, ih]; omega

/-- A move whose vertices pass the tests against the rows of a node respects what the nodes
of its path have forbidden. -/
theorem free_of_not_mem (a : Nat) : ∀ (l : List Nat), (mg.get a).1 ∉ forb_i mg s l →
    (mg.get a).1 ∉ forb_j mg s l → (mg.get a).2 ∉ forb_j mg s l → ∀ b ∈ l, Free mg s a b := by
  intro l
  induction l with
  | nil => intro _ _ _ b hb; cases hb
  | cons m rest ih =>
    intro h1 h2 h3 b hb
    simp only [forb_i, forb_j, List.mem_cons, not_or] at h1 h2 h3
    rcases List.mem_cons.1 hb with rfl | hb
    · exact ⟨⟨h1.1, h1.2.1, h2.1, h2.2.1, h2.2.2.1⟩, ⟨h3.1, h3.2.1, h3.2.2.1⟩⟩
    · exact ih h1.2.2 h2.2.2.2 h3.2.2.2 b hb

theorem loads_after_cons (m : Nat) (l : List Nat) (r : Nat) :
    loads_after I mg s (m :: l) r = loads_after I mg s l r + gain I mg s r m := by
  unfold loads_after
  rw [List.map_cons, List.sum_cons]
  ring

/-- The moves of a path leave the load of a route they do not touch as it is. -/
theorem loads_after_untouched (l : List Nat) (r : Nat) (h : r ∉ touched mg s l) :
    loads_after I mg s l r = (s.routes_list r).load := by
  induction l with
  | nil => simp [loads_after]
  | cons m rest ih =>
    simp only [touched, Finset.mem_insert, not_or] at h
    rw [loads_after_cons, ih h.2.2]
    unfold gain
    rw [if_neg h.1, if_neg h.2.1]
    ring

theorem head_touched (m : Nat) (l : List Nat) :
    (s.customers_list (mg.get m).2).route_ptr ∈ touched mg s (m :: l) := by
  simp [touched]

/-- A move between two routes is a proper relocation. -/
theorem proper_of_inter (hS : Served I s) {m : Nat} (h : Inter I mg s m) : Proper mg s m := by
  obtain ⟨⟨i0, i1⟩, ⟨j0, j1⟩, hr⟩ := h
  refine ⟨by omega, by omega, fun e => hr (by rw [e]), fun e => ?_, fun e => ?_⟩
  · have := (hS.forth _ i0 i1 (by rw [← e]; omega)).2
    rw [← e] at this
    exact hr this.symm
  · have := (hS.back _ j0 j1 (by rw [e]; omega)).2
    rw [e] at this
    exact hr this

/-- For a move between two routes the change of the stored cost by its relocation is the
delta of `compute_cost`. -/
theorem bracket_eq (hS : Served I s) {m : Nat} (h : Inter I mg s m)
    (hedge : mg.get_edge_cost m = I.cost (mg.get m).1 (mg.get m).2) :
    bracket I mg s m = compute_cost I mg s m := by
  obtain ⟨hi, hj, hij, hjn, hq⟩ := proper_of_inter hS h
  obtain ⟨⟨i0, i1⟩, ⟨j0, j1⟩, hr⟩ := h
  obtain ⟨c1, c2⟩ := hS.cc _ i0 i1
  unfold bracket compute_cost
  dsimp only
  rw [fallback_ne s _ hi, fallback_ne s _ hj, Solution.get_prev_vertex_ne _ _ hi,
    Solution.get_next_vertex_ne _ _ hi, Solution.get_prev_vertex_ne _ _ hj, if_pos hjn,
    Solution.get_cost_prev_vertex_ne _ _ hi, Solution.get_cost_prev_vertex_ne _ _ hj, c1, c2, hedge]
  ring

/-- Moves that respect what the earlier nodes of their path have forbidden are independent:
the later relocation reads nothing that the earlier one writes. -/
theorem indep_of_free (hS : Served I s) {a b : Nat} (ha : Inter I mg s a) (hb : Inter I mg s b)
    (h : Free mg s a b) : Indep mg s a b := by
  obtain ⟨⟨f1, f2, f3, f4, f5⟩, ⟨g1, g2, g3⟩⟩ := h
  obtain ⟨⟨a0, a1⟩, ⟨a2, a3⟩, _⟩ := ha
  obtain ⟨⟨b0, b1⟩, ⟨b2, b3⟩, _⟩ := hb
  refine ⟨⟨fun e => f5 e.symm, fun e => ?_, fun e => g3 e.symm, fun e => ?_, fun e => ?_⟩,
    ⟨fun e => f3 e.symm, fun e => ?_, fun e => g1 e.symm⟩⟩
  · have := (hS.forth _ a0 a1 (by rw [← e]; omega)).1
    rw [← e] at this
    exact f2 this.symm
  · have := (hS.back _ a0 a1 (by rw [← e]; omega)).1
    rw [← e] at this
    exact f4 this.symm
  · have := (hS.back _ a2 a3 (by rw [← e]; omega)).1
    rw [← e] at this
    exact g2 this.symm
  · have := (hS.forth _ a0 a1 (by rw [← e]; omega)).1
    rw [← e] at this
    exact f1 this.symm

theorem pairwise_indep (hS : Served I s) : ∀ (l : List Nat), (∀ m ∈ l, Inter I mg s m) →
    l.Pairwise (Free mg s) → l.Pairwise (Indep mg s) := by
  intro l hv hf
  induction l with
  | nil => exact List.Pairwise.nil
  | cons a rest ih =>
    obtain ⟨h1, h2⟩ := List.pairwise_cons.1 hf
    refine List.pairwise_cons.2 ⟨fun b hb => ?_, ih (fun m hm => hv m (List.mem_cons_of_mem _ hm)) h2⟩
    exact indep_of_free hS (hv a (List.mem_cons_self _ _)) (hv b (List.mem_cons_of_mem _ hb))
      (h1 b hb)

/-- The first vertices of the moves of a path are distinct. -/
theorem firsts_nodup : ∀ (l : List Nat), l.Pairwise (Free mg s) →
    (l.map (fun m => (mg.get m).1)).Nodup := by
  intro l hf
  induction l with
  | nil => simp
  | cons a rest ih =>
    obtain ⟨h1, h2⟩ := List.pairwise_cons.1 hf
    rw [List.map_cons, List.nodup_cons]
    refine ⟨fun hm => ?_, ih h2⟩
    obtain ⟨b, hb, e⟩ := List.mem_map.1 hm
    exact (h1 b hb).1.2.2.2.2 e.symm

end PathFacts

section Recorded

variable {I : Instance} {mg : MoveGenerators} {tolerance : Int} {s : Solution}
  {st : EjectionChain} {P : Nat → List Nat}

/-- The recorded chain of a node is its path. -/
theorem chain_eq : ∀ (n fuel : Nat), n < fuel → (∀ k, k ≤ n → NodeOK I mg tolerance s st P k) →
    chain st fuel (n : Int) = P n := by
  intro n
  induction n using Nat.strong_induction_on with
  | _ n ih =>
    intro fuel hf hall
    obtain ⟨f, rfl⟩ : ∃ f, fuel = f + 1 := ⟨fuel - 1, by omega⟩
    have hn := hall n (le_refl _)
    unfold chain
    rw [if_neg (by omega), Int.toNat_ofNat, hn.path]
    congr 1
    rcases hn.pred with e | ⟨e1, e2⟩
    · rw [if_pos e, e]
      cases f with
      | zero => rfl
      | succ f2 => unfold chain; rw [if_pos rfl]
    · have hne : st.predecessor n ≠ -1 := by omega
      rw [if_neg hne]
      obtain ⟨m, hm⟩ : ∃ m : Nat, st.predecessor n = (m : Int) := ⟨_, (Int.toNat_of_nonneg e1).symm⟩
      rw [hm, Int.toNat_ofNat]
      rw [hm] at e2
      have hmn : m < n := by omega
      exact ih m hmn f (by omega) (fun k hk => hall k (by omega))

/-- The loop of `execute` applies the relocations of the path of the node. -/
theorem execute_loop_eq : ∀ (n fuel : Nat) (t : Solution), n + 1 < fuel →
    (∀ k, k ≤ n → NodeOK I mg tolerance s st P k) →
    execute_loop I mg st fuel (n : Int) t = some (run I mg (P n) t) := by
  intro n
  induction n using Nat.strong_induction_on with
  | _ n ih =>
    intro fuel t hf hall
    obtain ⟨f, rfl⟩ : ∃ f, fuel = f + 1 := ⟨fuel - 1, by omega⟩
    have hn := hall n (le_refl _)
    unfold execute_loop
    rw [if_neg (by omega), Int.toNat_ofNat, hn.path]
    rcases hn.pred with e | ⟨e1, e2⟩
    · rw [if_pos e, e]
      obtain ⟨f2, rfl⟩ : ∃ f2, f = f2 + 1 := ⟨f - 1, by omega⟩
      unfold execute_loop
      rw [if_pos rfl]
      rfl
    · have hne : st.predecessor n ≠ -1 := by omega
      rw [if_neg hne]
      obtain ⟨m, hm⟩ : ∃ m : Nat, st.predecessor n = (m : Int) := ⟨_, (Int.toNat_of_nonneg e1).symm⟩
      rw [hm, Int.toNat_ofNat]
      rw [hm] at e2
      have hmn : m < n := by omega
      rw [ih m hmn f _ (by omega) (fun k hk => hall k (by omega))]
      rfl

end Recorded

end EjectionChain

/-! ## Creation of a relocation node -/

namespace EjectionChain

section Components

theorem forbid_i_ok {f : BitMatrix} {row : Nat} {S : List Int} (hm : f.realSize = 2 ^ 7)
    (h : f.RowOK row S) (hlen : S.length < 126) {a b : Int} (ha : 0 ≤ a ∧ a < 2147483647)
    (hb : 0 ≤ b ∧ b < 2147483647) :
    ∃ f2, forbid_i f row a b = some f2 ∧ f2.realSize = 2 ^ 7 ∧ f2.RowOK row (b :: a :: S) ∧
      ∀ r, r ≠ row → f2.data r = f.data r := by
  obtain ⟨f1, e1, m1, r1, o1⟩ := BitMatrix.set_ok hm h (by omega) ha
  obtain ⟨f2, e2, m2, r2, o2⟩ := BitMatrix.set_ok m1 r1 (by simp only [List.length_cons]; omega) hb
  refine ⟨f2, ?_, m2, r2, fun r hr => (o2 r hr).trans (o1 r hr)⟩
  unfold forbid_i
  rw [e1]
  exact e2

theorem forbid_j_ok {f : BitMatrix} {row : Nat} {S : List Int} (hm : f.realSize = 2 ^ 7)
    (h : f.RowOK row S) (hlen : S.length < 125) {a b c : Int} (ha : 0 ≤ a ∧ a < 2147483647)
    (hb : 0 ≤ b ∧ b < 2147483647) (hc : 0 ≤ c ∧ c < 2147483647) :
    ∃ f2, forbid_j f row a b c = some f2 ∧ f2.realSize = 2 ^ 7 ∧
      f2.RowOK row (c :: b :: a :: S) ∧ ∀ r, r ≠ row → f2.data r = f.data r := by
  obtain ⟨f1, e1, m1, r1, o1⟩ := BitMatrix.set_ok hm h (by omega) ha
  obtain ⟨f2, e2, m2, r2, o2⟩ := BitMatrix.set_ok m1 r1 (by simp only [List.length_cons]; omega) hb
  obtain ⟨f3, e3, m3, r3, o3⟩ := BitMatrix.set_ok m2 r2 (by simp only [List.length_cons]; omega) hc
  refine ⟨f3, ?_, m3, r3, fun r hr => ((o3 r hr).trans (o2 r hr)).trans (o1 r hr)⟩
  unfold forbid_j
  rw [e1]
  dsimp only
  rw [e2]
  exact e3

theorem forbid_all_ok {f : BitMatrix} {S : List Int} (hm : f.realSize = 2 ^ 7)
    (h : f.RowOK 0 S) (hlen : S.length < 100) {a b c d e : Int} (ha : 0 ≤ a ∧ a < 2147483647)
    (hb : 0 ≤ b ∧ b < 2147483647) (hc : 0 ≤ c ∧ c < 2147483647) (hd : 0 ≤ d ∧ d < 2147483647)
    (he : 0 ≤ e ∧ e < 2147483647) :
    ∃ f2, forbid_all f a b c d e = some f2 ∧ f2.realSize = 2 ^ 7 := by
  obtain ⟨f1, e1, m1, r1, _⟩ := BitMatrix.set_ok hm h (by omega) ha
  obtain ⟨f2, e2, m2, r2, _⟩ := BitMatrix.set_ok m1 r1 (by simp only [List.length_cons]; omega) hb
  obtain ⟨f3, e3, m3, r3, _⟩ := BitMatrix.set_ok m2 r2 (by simp only [List.length_cons]; omega) hc
  obtain ⟨f4, e4, m4, r4, _⟩ := BitMatrix.set_ok m3 r3 (by simp only [List.length_cons]; omega) hd
  obtain ⟨f5, e5, m5, _, _⟩ := BitMatrix.set_ok m4 r4 (by simp only [List.length_cons]; omega) he
  refine ⟨f5, ?_, m5⟩
  unfold forbid_all
  rw [e1]
  dsimp only
  rw [e2]
  dsimp only
  rw [e3]
  dsimp only
  rw [e4]
  exact e5

theorem MapOK_congr {buffer : Nat → Nat × Int} {K : Finset Nat} {f g : Nat → Int}
    (h : SmallFlatMap.MapOK buffer K f) (e : ∀ k ∈ K, f k = g k) :
    SmallFlatMap.MapOK buffer K g := by
  refine ⟨h.table, fun p hp hne => ?_⟩
  rw [h.vals p hp hne]
  rcases h.table.slots p hp with c | c
  · exact absurd c hne
  · exact e _ c

theorem set_loads_ok {buffer : Nat → Nat × Int} {K : Finset Nat} {f : Nat → Int}
    (h : SmallFlatMap.MapOK buffer K f) (hK : K.card < 30) {iRoute jRoute : Nat}
    (hi : iRoute ≠ 0) (hj : jRoute ≠ 0) (a c : Int) :
    ∃ b2, set_loads buffer iRoute a jRoute c = some b2 ∧
      SmallFlatMap.MapOK b2 (insert jRoute (insert iRoute K)) (upd (upd f iRoute a) jRoute c) := by
  obtain ⟨b1, e1, m1⟩ := h.assign_ok (by omega) hi a
  have hc1 : (insert iRoute K).card < 31 := by
    have := Finset.card_insert_le iRoute K
    omega
  obtain ⟨b2, e2, m2⟩ := m1.assign_ok hc1 hj c
  refine ⟨b2, ?_, m2⟩
  unfold set_loads
  rw [e1]
  exact e2

end Components

section Node

variable {I : Instance} {mg : MoveGenerators} {tolerance : Int} {s : Solution}

/-- A node whose fields and path are kept is still the end of its path. -/
theorem NodeOK.same_node {st st2 : EjectionChain} {P P2 : Nat → List Nat} {n : Nat}
    (h : NodeOK I mg tolerance s st P n)
    (e1 : st2.move n = st.move n) (e2 : st2.predecessor n = st.predecessor n)
    (e3 : st2.relo_heap.delta n = st.relo_heap.delta n)
    (e4 : st2.forbidden_i.data n = st.forbidden_i.data n)
    (e5 : st2.forbidden_i.realSize = st.forbidden_i.realSize)
    (e6 : st2.forbidden_j.data n = st.forbidden_j.data n)
    (e7 : st2.forbidden_j.realSize = st.forbidden_j.realSize)
    (e8 : st2.modified_routes_loads n = st.modified_routes_loads n)
    (eP : P2 n = P n)
    (eQ : st.predecessor n ≠ -1 → P2 (st.predecessor n).toNat = P (st.predecessor n).toNat) :
    NodeOK I mg tolerance s st2 P2 n := by
  refine ⟨?_, by rw [e2]; exact h.pred, by rw [eP]; exact h.len, by rw [eP]; exact h.card,
    by rw [eP]; exact h.inside, by rw [eP]; exact h.valid, by rw [eP]; exact h.free,
    by rw [e3, eP]; exact h.delta, by rw [e3]; exact h.le,
    by rw [eP]; exact h.fi.same_row e4 e5, by rw [eP]; exact h.fj.same_row e6 e7,
    by rw [eP, e8]; exact h.loads, by rw [eP, e1]; exact h.capped⟩
  rw [eP, e1, e2, h.path]
  by_cases c : st.predecessor n = -1
  · rw [if_pos c, if_pos c]
  · rw [if_neg c, if_neg c, eQ c]

end Node

end EjectionChain

/-! ## A new node keeps the invariant -/

namespace EjectionChain

section AddNode

variable {I : Instance} {mg : MoveGenerators} {tolerance : Int} {s : Solution}

theorem vertex_range (hN : (I.vertices_num : Int) ≤ 2147483647) {v : Int}
    (h : 0 ≤ v ∧ v < (I.vertices_num : Int)) : 0 ≤ v ∧ v < 2147483647 := ⟨h.1, by omega⟩

theorem served_ranges (hS : Served I s) (hN : (I.vertices_num : Int) ≤ 2147483647) {m : Nat}
    (h : Inter I mg s m) :
    (0 ≤ (mg.get m).1 ∧ (mg.get m).1 < 2147483647) ∧
    (0 ≤ (mg.get m).2 ∧ (mg.get m).2 < 2147483647) ∧
    (0 ≤ (s.customers_list (mg.get m).1).prev ∧ (s.customers_list (mg.get m).1).prev < 2147483647) ∧
    (0 ≤ (s.customers_list (mg.get m).1).next ∧ (s.customers_list (mg.get m).1).next < 2147483647) ∧
    (0 ≤ (s.customers_list (mg.get m).2).prev ∧ (s.customers_list (mg.get m).2).prev < 2147483647) := by
  obtain ⟨⟨i0, i1⟩, ⟨j0, j1⟩, _⟩ := h
  obtain ⟨⟨a1, a2, _⟩, ⟨a3, a4, _⟩⟩ := hS.range _ i0 i1
  obtain ⟨⟨b1, b2, _⟩, _⟩ := hS.range _ j0 j1
  exact ⟨⟨by omega, by omega⟩, ⟨by omega, by omega⟩, ⟨a1, by omega⟩, ⟨a3, by omega⟩, ⟨b1, by omega⟩⟩

/-- The loads after a path extended by a move between two routes. -/
theorem loads_after_step {l : List Nat} {mv : Nat}
    (hne : (s.customers_list (mg.get mv).1).route_ptr ≠ (s.customers_list (mg.get mv).2).route_ptr)
    (k : Nat) :
    loads_after I mg s (mv :: l) k =
      upd (upd (loads_after I mg s l) (s.customers_list (mg.get mv).1).route_ptr
        (loads_after I mg s l (s.customers_list (mg.get mv).1).route_ptr - I.demand (mg.get mv).1))
        (s.customers_list (mg.get mv).2).route_ptr
        (loads_after I mg s l (s.customers_list (mg.get mv).2).route_ptr + I.demand (mg.get mv).1)
        k := by
  rw [loads_after_cons]
  unfold gain
  by_cases c1 : k = (s.customers_list (mg.get mv).2).route_ptr
  · rw [c1, upd_same, if_pos rfl, if_neg (fun e => hne e.symm)]
    ring
  · rw [upd_other _ _ _ _ c1, if_neg c1]
    by_cases c2 : k = (s.customers_list (mg.get mv).1).route_ptr
    · rw [c2, upd_same, if_pos rfl]
      ring
    · rw [upd_other _ _ _ _ c2, if_neg c2]
      ring

/-- The statements that create a relocation node keep the invariant of the search: the new
node is the end of the path of the popped node extended by the move. -/
theorem add_node_ok (hS : Served I s) (hN : (I.vertices_num : Int) ≤ 2147483647)
    {st : EjectionChain} {P : Nat → List Nat} (hinv : SearchInv I mg tolerance s st P)
    {curr : Nat} (hcurr : curr < st.rni) {iRoute : Nat} {iRoute_load : Int}
    (hctx : Ctx I mg s P curr iRoute iRoute_load)
    {mv : Nat} (hmv : mv < mg.moves.length) (hI : Inter I mg s mv)
    (hri : (s.customers_list (mg.get mv).1).route_ptr = iRoute)
    (h1 : (mg.get mv).1 ∉ forb_i mg s (P curr)) (h2 : (mg.get mv).1 ∉ forb_j mg s (P curr))
    (h3 : (mg.get mv).2 ∉ forb_j mg s (P curr))
    (hcap : iRoute_load - I.demand (mg.get mv).1 ≤ I.vehicle_capacity)
    {jLoad : Int}
    (hjl : jLoad = loads_after I mg s (P curr) (s.customers_list (mg.get mv).2).route_ptr)
    (hexact : st.moves_heap.delta mv = compute_cost I mg s mv)
    (hle : st.moves_heap.delta mv + st.relo_heap.delta curr ≤ -tolerance) :
    ∃ st2, add_node st curr mv iRoute iRoute_load (s.customers_list (mg.get mv).2).route_ptr jLoad
        (I.demand (mg.get mv).1) (s.customers_list (mg.get mv).1).prev (mg.get mv).1
        (s.customers_list (mg.get mv).1).next (s.customers_list (mg.get mv).2).prev
        (mg.get mv).2 = some st2 ∧
      st2.rni = st.rni ∧ st2.feasible_rni = st.feasible_rni ∧ st2.moves_heap = st.moves_heap ∧
      st2.computed = st.computed ∧ st2.forbidden_i.realSize = 2 ^ 7 ∧
      st2.forbidden_j.realSize = 2 ^ 7 ∧ st2.relo_heap.OK ∧
      st2.relo_heap.size = st.relo_heap.size + 1 ∧
      (∀ n, st.rni < n → st2.relo_heap.heap_index n = -1) ∧
      (∀ n, n ≤ st.rni → NodeOK I mg tolerance s st2 (upd P st.rni (mv :: P curr)) n) ∧
      loads_after I mg s (mv :: P curr) (s.customers_list (mg.get mv).2).route_ptr =
        jLoad + I.demand (mg.get mv).1 := by
  have hc := hinv.nodes curr hcurr
  obtain ⟨mc, rest, hP, hiR⟩ := hctx.head
  obtain ⟨ri, rj, rp, rn, rq⟩ := served_ranges hS hN hI
  obtain ⟨⟨i0, i1⟩, ⟨j0, j1⟩, hne⟩ := hI
  have hlt := hinv.rni_lt
  have hlen := hc.len
  have hcard := hc.card
  have hiK : iRoute ∈ touched mg s (P curr) := by
    rw [hP, hiR]
    exact head_touched mc rest
  -- the rows
  obtain ⟨o1, o2, o3⟩ := @BitMatrix.overwrite_ok st.forbidden_i curr st.rni _ hc.fi
  obtain ⟨fi, efi, mfi, rfi, ofi⟩ := forbid_i_ok (o2.trans hinv.size_i) o1
    (by rw [forb_i_length]; omega) rp rq
  obtain ⟨p1, p2, p3⟩ := @BitMatrix.overwrite_ok st.forbidden_j curr st.rni _ hc.fj
  obtain ⟨fj, efj, mfj, rfj, ofj⟩ := forbid_j_ok (p2.trans hinv.size_j) p1
    (by rw [forb_j_length]; omega) ri rn rj
  -- the loads
  have hi0 : iRoute ≠ 0 := by rw [← hri]; exact (hS.ptr _ i0 i1).1
  have hj0 : (s.customers_list (mg.get mv).2).route_ptr ≠ 0 := (hS.ptr _ j0 j1).1
  obtain ⟨b, eb, mb⟩ := set_loads_ok hc.loads (by omega) hi0 hj0
    (iRoute_load - I.demand (mg.get mv).1) (jLoad + I.demand (mg.get mv).1)
  -- the heap
  have hout := hinv.out st.rni (le_refl _)
  have hok1 := MGHeap.set_delta_ok st.relo_heap st.rni
    (st.relo_heap.delta curr + st.moves_heap.delta mv) hinv.heap hout
  obtain ⟨h, eh, hok, hsize, hdelta, _, hidx⟩ := MGHeap.insert_ok _ st.rni hok1 hout
  have hloads : ∀ k, loads_after I mg s (mv :: P curr) k =
      upd (upd (loads_after I mg s (P curr)) iRoute (iRoute_load - I.demand (mg.get mv).1))
        (s.customers_list (mg.get mv).2).route_ptr (jLoad + I.demand (mg.get mv).1) k := by
    intro k
    rw [loads_after_step hne k, hri, hjl, hctx.load]
  refine ⟨{ st with move := upd st.move st.rni mv, forbidden_i := fi, forbidden_j := fj,
                    modified_routes_loads := upd st.modified_routes_loads st.rni b,
                    predecessor := upd st.predecessor st.rni (curr : Int), relo_heap := h },
    ?_, rfl, rfl, rfl, rfl, mfi, mfj, hok, hsize, fun n hn => ?_, fun n hn => ?_, ?_⟩
  · unfold add_node
    rw [efi]
    dsimp only
    rw [efj]
    dsimp only
    rw [eb]
    dsimp only
    rw [eh]
  · exact hidx n (by omega) (hinv.out n (by omega))
  · have hdn : ∀ k, h.delta k = upd st.relo_heap.delta st.rni
        (st.relo_heap.delta curr + st.moves_heap.delta mv) k := by
      intro k; rw [hdelta]; rfl
    by_cases c : n = st.rni
    · subst c
      have hcn : (curr : Int) ≠ -1 := by omega
      have epred : upd st.predecessor st.rni (curr : Int) st.rni = (curr : Int) := upd_same _ _ _
      have hpred : (0 : Int) ≤ upd st.predecessor st.rni (curr : Int) st.rni ∧
          upd st.predecessor st.rni (curr : Int) st.rni < (st.rni : Int) := by
        rw [epred]
        exact ⟨by omega, by exact_mod_cast hcurr⟩
      refine ⟨?_, Or.inr hpred, ?_, ?_, ?_, ?_, ?_, ?_, ?_, ?_, ?_, ?_, ?_⟩
      · show upd P st.rni (mv :: P curr) st.rni =
          upd st.move st.rni mv st.rni ::
            (if upd st.predecessor st.rni (curr : Int) st.rni = -1 then []
             else upd P st.rni (mv :: P curr) (upd st.predecessor st.rni (curr : Int) st.rni).toNat)
        rw [upd_same, upd_same, upd_same, if_neg hcn, Int.toNat_ofNat,
          upd_other _ _ _ _ (by omega : curr ≠ st.rni)]
      · rw [upd_same, List.length_cons]; omega
      · rw [upd_same, List.length_cons]
        show (insert _ (insert _ (touched mg s (P curr)))).card ≤ _
        rw [hri, Finset.insert_eq_of_mem hiK]
        have := Finset.card_insert_le (s.customers_list (mg.get mv).2).route_ptr
          (touched mg s (P curr))
        omega
      · rw [upd_same]
        intro m hm
        rcases List.mem_cons.1 hm with rfl | hm
        · exact hmv
        · exact hc.inside m hm
      · rw [upd_same]
        intro m hm
        rcases List.mem_cons.1 hm with rfl | hm
        · exact ⟨⟨i0, i1⟩, ⟨j0, j1⟩, hne⟩
        · exact hc.valid m hm
      · rw [upd_same]
        exact List.pairwise_cons.2 ⟨free_of_not_mem mv (P curr) h1 h2 h3, hc.free⟩
      · show h.delta st.rni = _
        rw [hdn, upd_same, upd_same, List.map_cons, List.sum_cons, hc.delta, hexact]
        ring
      · show h.delta st.rni ≤ _
        rw [hdn, upd_same]
        linarith
      · rw [upd_same]
        exact rfi
      · rw [upd_same]
        exact rfj
      · rw [upd_same]
        show SmallFlatMap.MapOK (upd st.modified_routes_loads st.rni b st.rni) _ _
        rw [upd_same]
        have mb2 : SmallFlatMap.MapOK b (touched mg s (mv :: P curr))
            (upd (upd (loads_after I mg s (P curr)) iRoute
              (iRoute_load - I.demand (mg.get mv).1)) (s.customers_list (mg.get mv).2).route_ptr
              (jLoad + I.demand (mg.get mv).1)) := by
          show SmallFlatMap.MapOK b (insert _ (insert _ _)) _
          rw [hri]
          exact mb
        exact MapOK_congr mb2 (fun k _ => (hloads k).symm)
      · rw [upd_same]
        show ∀ r ∈ touched mg s (mv :: P curr),
          r ≠ (s.customers_list (mg.get (upd st.move st.rni mv st.rni)).2).route_ptr → _
        rw [upd_same]
        intro r hr hrj
        rw [hloads r, upd_other _ _ _ _ hrj]
        by_cases c2 : r = iRoute
        · rw [c2, upd_same]
          exact hcap
        · rw [upd_other _ _ _ _ c2]
          have hrK : r ∈ touched mg s (P curr) := by
            simp only [touched, Finset.mem_insert] at hr
            rcases hr with e | e | e
            · exact absurd e hrj
            · exact absurd (e.trans hri) c2
            · exact e
          refine hc.capped r hrK ?_
          have : st.move curr = mc := by
            have := hc.path
            rw [hP] at this
            exact (List.cons.inj this).1.symm
          rw [this, ← hiR]
          exact c2
    · have hn2 : n < st.rni := by omega
      have hnn := hinv.nodes n hn2
      refine hnn.same_node (upd_other _ _ _ _ c) (upd_other _ _ _ _ c) ?_ ?_ (mfi.trans hinv.size_i.symm)
        ?_ (mfj.trans hinv.size_j.symm) (upd_other _ _ _ _ c) (upd_other _ _ _ _ c) (fun hp => ?_)
      · show h.delta n = _
        rw [hdn, upd_other _ _ _ _ c]
      · exact (ofi n c).trans (o3 n c)
      · exact (ofj n c).trans (p3 n c)
      · rcases hnn.pred with e | ⟨e1, e2⟩
        · exact absurd e hp
        · refine upd_other _ _ _ _ ?_
          have := Int.toNat_of_nonneg e1
          omega
  · rw [hloads, upd_same]

end AddNode

end EjectionChain

/-! ## One move generator of the search -/

namespace EjectionChain

section TryMove

variable {I : Instance} {mg : MoveGenerators} {tolerance : Int} {s : Solution}

/-- The lambda `jRoute_load` returns the load of the route after the moves of the path. -/
theorem jRoute_load_ok {st : EjectionChain} {P : Nat → List Nat} {curr : Nat}
    (hc : NodeOK I mg tolerance s st P curr) (hlen : (P curr).length < 25) {jRoute : Nat}
    (hj : jRoute ≠ 0) :
    jRoute_load s st curr jRoute = some (loads_after I mg s (P curr) jRoute) := by
  have hcard := hc.card
  obtain ⟨p, e, _, p1, p2⟩ := hc.loads.find_ok (by omega) hj
  unfold jRoute_load
  rw [e]
  dsimp only
  by_cases c : jRoute ∈ touched mg s (P curr)
  · obtain ⟨a1, a2⟩ := p1 c
    rw [if_pos (by rw [a1]; exact hj), a2]
  · rw [if_neg (by rw [p2 c]; exact fun h => h rfl), loads_after_untouched _ _ c]
    rfl

/-- A state that differs in the fields of the move generators only. -/
theorem SearchInv.moves {st : EjectionChain} {P : Nat → List Nat}
    (h : SearchInv I mg tolerance s st P) (mh : MGHeap) (cp : Nat → Bool) (cl : List Nat)
    (hex : ∀ m, (mh.heap_index m ≠ -1 ∨ cp m = true) → mh.delta m = compute_cost I mg s m) :
    SearchInv I mg tolerance s
      { st with moves_heap := mh, computed := cp, computed_for_ejch := cl } P :=
  ⟨h.rni_lt, fun n hn => (h.nodes n hn).same_node rfl rfl rfl rfl rfl rfl rfl rfl rfl (fun _ => rfl),
    h.heap, h.out, h.infeasible, hex, h.size_i, h.size_j⟩

/-- The delta that the search uses for a move between two routes is that of
`compute_cost`. -/
theorem refresh_delta_ok (hS : Served I s) {st : EjectionChain} {P : Nat → List Nat}
    (hinv : SearchInv I mg tolerance s st P) {mv : Nat} (hI : Inter I mg s mv) (c : Bool × Int)
    (hc : c.1 = true → c.2 = -s.get_cost_prev_customer (mg.get mv).1
      - s.get_cost_prev_vertex (s.customers_list (mg.get mv).1).route_ptr
          (s.customers_list (mg.get mv).1).next
      + I.cost (s.customers_list (mg.get mv).1).prev (s.customers_list (mg.get mv).1).next) :
    ∃ mh cp cl c2,
      refresh_delta I mg s (s.customers_list (mg.get mv).1).route_ptr
        (s.customers_list (mg.get mv).1).prev (mg.get mv).1 (s.customers_list (mg.get mv).1).next
        (s.customers_list (mg.get mv).2).prev (mg.get mv).2 mv c st =
        ({ st with moves_heap := mh, computed := cp, computed_for_ejch := cl }, c2) ∧
      (∀ m, (mh.heap_index m ≠ -1 ∨ cp m = true) → mh.delta m = compute_cost I mg s m) ∧
      mh.delta mv = compute_cost I mg s mv ∧
      (c2.1 = true → c2.2 = -s.get_cost_prev_customer (mg.get mv).1
        - s.get_cost_prev_vertex (s.customers_list (mg.get mv).1).route_ptr
            (s.customers_list (mg.get mv).1).next
        + I.cost (s.customers_list (mg.get mv).1).prev (s.customers_list (mg.get mv).1).next) := by
  obtain ⟨hi, hj, hij, hjn, hq⟩ := proper_of_inter hS hI
  have hcc : compute_cost I mg s mv =
      (-s.get_cost_prev_customer (mg.get mv).1
        - s.get_cost_prev_vertex (s.customers_list (mg.get mv).1).route_ptr
            (s.customers_list (mg.get mv).1).next
        + I.cost (s.customers_list (mg.get mv).1).prev (s.customers_list (mg.get mv).1).next)
      - s.get_cost_prev_customer (mg.get mv).2 +
        I.cost (s.customers_list (mg.get mv).2).prev (mg.get mv).1 + mg.get_edge_cost mv := by
    unfold compute_cost
    dsimp only
    rw [fallback_ne s _ hi, fallback_ne s _ hj, Solution.get_prev_vertex_ne _ _ hi,
      Solution.get_next_vertex_ne _ _ hi, Solution.get_prev_vertex_ne _ _ hj, if_pos hjn,
      Solution.get_cost_prev_vertex_ne _ _ hi, Solution.get_cost_prev_vertex_ne _ _ hj]
    unfold Solution.get_cost_prev_customer
    ring
  unfold refresh_delta
  by_cases g : st.moves_heap.heap_index mv = -1 ∧ st.computed mv = false
  · rw [if_pos g]
    refine ⟨_, _, _, _, rfl, fun m hm => ?_, ?_, fun _ => ?_⟩
    · by_cases e : m = mv
      · rw [e]
        show upd st.moves_heap.delta mv _ mv = _
        rw [upd_same, hcc]
        by_cases c1 : c.1 = false
        · rw [if_pos c1]
        · rw [if_neg c1, hc (by simpa using c1)]
      · have h2 : st.moves_heap.heap_index m ≠ -1 ∨ st.computed m = true := by
          rcases hm with h3 | h3
          · exact Or.inl h3
          · right
            have : upd st.computed mv true m = true := h3
            rwa [upd_other _ _ _ _ e] at this
        show upd st.moves_heap.delta mv _ m = _
        rw [upd_other _ _ _ _ e]
        exact hinv.exact m h2
    · show upd st.moves_heap.delta mv _ mv = _
      rw [upd_same, hcc]
      by_cases c1 : c.1 = false
      · rw [if_pos c1]
      · rw [if_neg c1, hc (by simpa using c1)]
    · dsimp only
      by_cases c1 : c.1 = false
      · rw [if_pos c1]
      · rw [if_neg c1, hc (by simpa using c1)]
  · rw [if_neg g]
    refine ⟨st.moves_heap, st.computed, st.computed_for_ejch, c, rfl, hinv.exact, ?_, hc⟩
    refine hinv.exact mv ?_
    by_contra h2
    push_neg at h2
    exact g ⟨h2.1, by simpa using h2.2⟩

end TryMove

end EjectionChain

/-! ## The loop over the move generators of a customer -/

namespace EjectionChain

section MoveLoop

variable {I : Instance} {mg : MoveGenerators} {tolerance : Int} {s : Solution}

theorem step_same {st st2 : EjectionChain} {P : Nat → List Nat}
    (h : SearchInv I mg tolerance s st2 P) (e1 : st2.rni = st.rni)
    (e2 : st2.relo_heap.size = st.relo_heap.size) : Step I mg tolerance s st P (st2, false) :=
  ⟨P, fun _ _ => rfl, by rw [e1], fun _ => ⟨h, by rw [e1, e2]⟩, fun c => by cases c⟩

/-- A part of the search after another part that went on. -/
theorem step_comp {st st2 : EjectionChain} {P P2 : Nat → List Nat} {r : EjectionChain × Bool}
    (a1 : ∀ n, n < st.rni → P2 n = P n) (a2 : st.rni ≤ st2.rni)
    (b2 : st2.relo_heap.size + st.rni = st.relo_heap.size + st2.rni)
    (h : Step I mg tolerance s st2 P2 r) : Step I mg tolerance s st P r := by
  obtain ⟨P3, c1, c2, c3, c4⟩ := h
  refine ⟨P3, fun n hn => (c1 n (by omega)).trans (a1 n hn), by omega, fun hr => ?_, c4⟩
  obtain ⟨d1, d2⟩ := c3 hr
  exact ⟨d1, by omega⟩

/-- One pass through the body of the loop over the move generators of customer `i` of the
route of the popped node. -/
theorem try_move_ok (hS : Served I s) (hN : (I.vertices_num : Int) ≤ 2147483647)
    (hrange : ∀ m, m < mg.moves.length →
      0 ≤ (mg.get m).2 ∧ (mg.get m).2 < (I.vertices_num : Int))
    {st : EjectionChain} {P : Nat → List Nat} (hinv : SearchInv I mg tolerance s st P)
    {curr : Nat} (hcurr : curr < st.rni) {iRoute : Nat} {iRoute_load : Int}
    (hctx : Ctx I mg s P curr iRoute iRoute_load)
    {mv : Nat} (hmv : mv < mg.moves.length)
    (hi0 : 0 < (mg.get mv).1) (hi1 : (mg.get mv).1 < (I.vertices_num : Int))
    (hri : (s.customers_list (mg.get mv).1).route_ptr = iRoute)
    (h1 : (mg.get mv).1 ∉ forb_i mg s (P curr)) (h2 : (mg.get mv).1 ∉ forb_j mg s (P curr))
    (hcap : iRoute_load - I.demand (mg.get mv).1 ≤ I.vehicle_capacity) (c : Bool × Int)
    (hc : c.1 = true → c.2 = -s.get_cost_prev_customer (mg.get mv).1
      - s.get_cost_prev_vertex (s.customers_list (mg.get mv).1).route_ptr
          (s.customers_list (mg.get mv).1).next
      + I.cost (s.customers_list (mg.get mv).1).prev (s.customers_list (mg.get mv).1).next) :
    ∃ st2 c2 b, try_move I mg tolerance s curr iRoute iRoute_load (mg.get mv).1
        (s.customers_list (mg.get mv).1).prev (s.customers_list (mg.get mv).1).next mv c st =
        some (st2, c2, b) ∧
      (c2.1 = true → c2.2 = -s.get_cost_prev_customer (mg.get mv).1
        - s.get_cost_prev_vertex (s.customers_list (mg.get mv).1).route_ptr
            (s.customers_list (mg.get mv).1).next
        + I.cost (s.customers_list (mg.get mv).1).prev (s.customers_list (mg.get mv).1).next) ∧
      Step I mg tolerance s st P (st2, b) := by
  subst hri
  have hcN := hinv.nodes curr hcurr
  have hlt := hinv.rni_lt
  have hlen : (P curr).length < 25 := by
    have := hcN.len
    omega
  have hjr := hrange mv hmv
  unfold try_move
  dsimp only
  by_cases hj : (mg.get mv).2 = 0
  · rw [if_pos hj]
    exact ⟨st, c, false, rfl, hc, step_same hinv rfl rfl⟩
  rw [if_neg hj, BitMatrix.is_set_ok hinv.size_j hcN.fj (by rw [forb_j_length]; omega)
    (vertex_range hN hjr)]
  by_cases h3 : (mg.get mv).2 ∈ forb_j mg s (P curr)
  · rw [decide_eq_true h3]
    exact ⟨st, c, false, rfl, hc, step_same hinv rfl rfl⟩
  rw [decide_eq_false h3]
  dsimp only
  unfold Solution.get_route_index
  by_cases hr : (s.customers_list (mg.get mv).2).route_ptr =
      (s.customers_list (mg.get mv).1).route_ptr
  · rw [if_pos hr]
    exact ⟨st, c, false, rfl, hc, step_same hinv rfl rfl⟩
  rw [if_neg hr]
  have hj0 : 0 < (mg.get mv).2 := by omega
  have hI : Inter I mg s mv := ⟨⟨hi0, hi1⟩, ⟨hj0, hjr.2⟩, fun e => hr e.symm⟩
  rw [jRoute_load_ok hcN hlen (hS.ptr _ hj0 hjr.2).1]
  dsimp only
  rw [Solution.get_prev_vertex_ne _ _ hj]
  obtain ⟨mh, cp, cl, c2, er, hex, hd, hc2⟩ := refresh_delta_ok hS hinv hI c hc
  rw [er]
  dsimp only
  have hinv2 := hinv.moves mh cp cl hex
  by_cases hp : mh.delta mv + st.relo_heap.delta curr > -tolerance
  · rw [if_pos hp]
    exact ⟨_, c2, false, rfl, hc2, step_same hinv2 rfl rfl⟩
  rw [if_neg hp]
  obtain ⟨st2, e2, q1, q2, q3, q4, q5, q6, q7, q8, q9, q10, q11⟩ :=
    add_node_ok hS hN hinv2 hcurr hctx hmv hI rfl h1 h2 h3 hcap rfl hd (by linarith)
  rw [e2]
  dsimp only
  have q1b : st2.rni = st.rni := q1
  have hP2 : ∀ n, n < st.rni → upd P st.rni (mv :: P curr) n = P n :=
    fun n hn => upd_other _ _ _ _ (by omega)
  by_cases hfe : loads_after I mg s (P curr) (s.customers_list (mg.get mv).2).route_ptr +
      I.demand (mg.get mv).1 ≤ I.vehicle_capacity
  · rw [if_pos hfe]
    refine ⟨_, c2, true, rfl, hc2, upd P st.rni (mv :: P curr), hP2, ?_, fun hb => Bool.noConfusion hb,
      fun _ => Or.inl ?_⟩
    · show st.rni ≤ st2.rni
      omega
    · refine ⟨?_, rfl, fun n hn => ?_, ?_, ⟨q7.linked, q5, q6⟩⟩
      · show st2.rni < 25
        omega
      · have hn2 : n ≤ st.rni := by
          have : n ≤ st2.rni := hn
          omega
        exact (q10 n hn2).same_node rfl rfl rfl rfl rfl rfl rfl rfl rfl (fun _ => rfl)
      · show ∀ r ∈ touched mg s (upd P st.rni (mv :: P curr) st2.rni), _
        rw [q1b, upd_same]
        intro r hr2
        by_cases e : r = (s.customers_list (mg.get mv).2).route_ptr
        · rw [e, q11]
          exact hfe
        · have hnode := q10 st.rni (le_refl _)
          have hm : st2.move st.rni = mv := by
            have := hnode.path
            rw [upd_same] at this
            exact (List.cons.inj this).1.symm
          have := hnode.capped r (by rw [upd_same]; exact hr2) (by rw [hm]; exact e)
          rwa [upd_same] at this
  · rw [if_neg hfe]
    have hinv3 : st2.rni + 1 ≠ 25 →
        SearchInv I mg tolerance s { st2 with rni := st2.rni + 1 } (upd P st.rni (mv :: P curr)) := by
      intro hne
      refine ⟨?_, fun n hn => ?_, q7, fun n hn => ?_, ?_, ?_, q5, q6⟩
      · show st2.rni + 1 < 25
        omega
      · have hn2 : n ≤ st.rni := by
          have : n < st2.rni + 1 := hn
          omega
        exact (q10 n hn2).same_node rfl rfl rfl rfl rfl rfl rfl rfl rfl (fun _ => rfl)
      · have : st2.rni + 1 ≤ n := hn
        exact q9 n (by omega)
      · show st2.feasible_rni = -1
        rw [q2]
        exact hinv.infeasible
      · show ∀ m, (st2.moves_heap.heap_index m ≠ -1 ∨ st2.computed m = true) →
          st2.moves_heap.delta m = compute_cost I mg s m
        rw [q3, q4]
        exact hex
    refine ⟨_, c2, _, rfl, hc2, upd P st.rni (mv :: P curr), hP2, ?_, fun hb => ?_, fun hb => ?_⟩
    · show st.rni ≤ st2.rni + 1
      omega
    · have hne : st2.rni + 1 ≠ 25 := by
        intro e
        have : decide (st2.rni + 1 = max_relocation_nodes) = false := hb
        rw [decide_eq_false_iff_not] at this
        exact this e
      refine ⟨hinv3 hne, ?_⟩
      show st2.relo_heap.size + st.rni = st.relo_heap.size + (st2.rni + 1)
      have : st2.relo_heap.size = st.relo_heap.size + 1 := q8
      omega
    · right
      refine ⟨?_, ⟨q7.linked, q5, q6⟩⟩
      show st2.feasible_rni = -1
      rw [q2]
      exact hinv.infeasible

/-- The loop over the move generators of customer `i` of the route of the popped node. -/
theorem move_loop_ok (hS : Served I s) (hN : (I.vertices_num : Int) ≤ 2147483647)
    (hrange : ∀ m, m < mg.moves.length →
      0 ≤ (mg.get m).2 ∧ (mg.get m).2 < (I.vertices_num : Int))
    {curr : Nat} {iRoute : Nat} {iRoute_load : Int} {i : Int}
    (hi0 : 0 < i) (hi1 : i < (I.vertices_num : Int))
    (hri : (s.customers_list i).route_ptr = iRoute)
    (hcap : iRoute_load - I.demand i ≤ I.vehicle_capacity) :
    ∀ (l : List Nat) (c : Bool × Int) (st : EjectionChain) (P : Nat → List Nat),
      (∀ m ∈ l, m < mg.moves.length ∧ (mg.get m).1 = i) →
      SearchInv I mg tolerance s st P → curr < st.rni → Ctx I mg s P curr iRoute iRoute_load →
      i ∉ forb_i mg s (P curr) → i ∉ forb_j mg s (P curr) →
      (c.1 = true → c.2 = -s.get_cost_prev_customer i
        - s.get_cost_prev_vertex (s.customers_list i).route_ptr (s.customers_list i).next
        + I.cost (s.customers_list i).prev (s.customers_list i).next) →
      ∃ r, move_loop I mg tolerance s curr iRoute iRoute_load i (s.customers_list i).prev
          (s.customers_list i).next l c st = some r ∧ Step I mg tolerance s st P r := by
  intro l
  induction l with
  | nil =>
    intro c st P _ hinv _ _ _ _ _
    exact ⟨(st, false), rfl, step_same hinv rfl rfl⟩
  | cons mv rest ih =>
    intro c st P hl hinv hcurr hctx h1 h2 hc
    obtain ⟨hmv, hf⟩ := hl mv (List.mem_cons_self _ _)
    subst hf
    obtain ⟨st2, c2, b, e, hc2, hstep⟩ := try_move_ok hS hN hrange hinv hcurr hctx hmv hi0 hi1 hri
      h1 h2 hcap c hc
    unfold move_loop
    rw [e]
    cases b with
    | true => exact ⟨(st2, true), rfl, hstep⟩
    | false =>
      dsimp only
      have hstep2 := hstep
      obtain ⟨P2, a1, a2, a3, _⟩ := hstep2
      obtain ⟨b1, b2⟩ := a3 rfl
      have a2b : st.rni ≤ st2.rni := a2
      have hPc : P2 curr = P curr := a1 curr hcurr
      obtain ⟨r, er, hr⟩ := ih c2 st2 P2 (fun m hm => hl m (List.mem_cons_of_mem _ hm)) b1
        (by omega) ⟨by rw [hPc]; exact hctx.head, by rw [hPc]; exact hctx.load⟩
        (by rw [hPc]; exact h1) (by rw [hPc]; exact h2) hc2
      exact ⟨r, er, step_comp a1 a2 b2 hr⟩

end MoveLoop

end EjectionChain

/-! ## The loops over the customers of a route and over the heap of nodes -/

namespace EjectionChain

section Loops

variable {I : Instance} {mg : MoveGenerators} {tolerance : Int} {s : Solution}

/-- One pass through the body of the loop over the customers of the route of the popped
node. -/
theorem try_customer_ok (hS : Served I s) (hN : (I.vertices_num : Int) ≤ 2147483647)
    (hrange : ∀ m, m < mg.moves.length →
      0 ≤ (mg.get m).2 ∧ (mg.get m).2 < (I.vertices_num : Int))
    (hact : ∀ v : Int, 0 < v → v < (I.vertices_num : Int) →
      ∀ m ∈ mg.get_move_generator_indices_involving_1st v,
        m < mg.moves.length ∧ (mg.get m).1 = v)
    {st : EjectionChain} {P : Nat → List Nat} (hinv : SearchInv I mg tolerance s st P)
    {curr : Nat} (hcurr : curr < st.rni) {iRoute : Nat} {iRoute_load : Int}
    (hctx : Ctx I mg s P curr iRoute iRoute_load) {i : Int}
    (hi0 : 0 < i) (hi1 : i < (I.vertices_num : Int))
    (hri : (s.customers_list i).route_ptr = iRoute) :
    ∃ r, try_customer I mg tolerance s curr iRoute iRoute_load i st = some r ∧
      Step I mg tolerance s st P r := by
  have hcN := hinv.nodes curr hcurr
  have hlt := hinv.rni_lt
  have hlen : (P curr).length < 25 := by
    have := hcN.len
    omega
  have hir := vertex_range hN ⟨le_of_lt hi0, hi1⟩
  unfold try_customer
  by_cases hc : iRoute_load - I.demand i > I.vehicle_capacity
  · rw [if_pos hc]
    exact ⟨_, rfl, step_same hinv rfl rfl⟩
  rw [if_neg hc, BitMatrix.is_set_ok hinv.size_i hcN.fi (by rw [forb_i_length]; omega) hir]
  by_cases h1 : i ∈ forb_i mg s (P curr)
  · rw [decide_eq_true h1]
    exact ⟨_, rfl, step_same hinv rfl rfl⟩
  rw [decide_eq_false h1]
  dsimp only
  rw [BitMatrix.is_set_ok hinv.size_j hcN.fj (by rw [forb_j_length]; omega) hir]
  by_cases h2 : i ∈ forb_j mg s (P curr)
  · rw [decide_eq_true h2]
    exact ⟨_, rfl, step_same hinv rfl rfl⟩
  rw [decide_eq_false h2]
  dsimp only
  rw [Solution.get_prev_vertex_ne _ _ (ne_of_gt hi0), Solution.get_next_vertex_ne _ _ (ne_of_gt hi0)]
  exact move_loop_ok hS hN hrange hi0 hi1 hri (not_lt.1 hc) _ (false, 0) st P (hact i hi0 hi1) hinv
    hcurr hctx h1 h2 (fun h => Bool.noConfusion h)

/-- The loop over the customers of the route of the popped node, along the walk from a
customer of the route to the depot. -/
theorem customer_loop_ok (hS : Served I s) (hN : (I.vertices_num : Int) ≤ 2147483647)
    (hrange : ∀ m, m < mg.moves.length →
      0 ≤ (mg.get m).2 ∧ (mg.get m).2 < (I.vertices_num : Int))
    (hact : ∀ v : Int, 0 < v → v < (I.vertices_num : Int) →
      ∀ m ∈ mg.get_move_generator_indices_involving_1st v,
        m < mg.moves.length ∧ (mg.get m).1 = v)
    {curr : Nat} {iRoute : Nat} {iRoute_load : Int} :
    ∀ (t : List Int) (x : Int) (fuel : Nat) (st : EjectionChain) (P : Nat → List Nat),
      NextChain (fun u => (s.customers_list u).next) x t 0 →
      (∀ u ∈ x :: t, 0 < u ∧ u < (I.vertices_num : Int) ∧
        (s.customers_list u).route_ptr = iRoute) →
      t.length + 1 < fuel → SearchInv I mg tolerance s st P → curr < st.rni →
      Ctx I mg s P curr iRoute iRoute_load →
      ∃ r, customer_loop I mg tolerance s curr iRoute iRoute_load fuel x st = some r ∧
        Step I mg tolerance s st P r := by
  intro t
  induction t with
  | nil =>
    intro x fuel st P hch hall hf hinv hcurr hctx
    obtain ⟨f, rfl⟩ : ∃ f, fuel = f + 2 := ⟨fuel - 2, by simp at hf; omega⟩
    obtain ⟨x0, x1, xr⟩ := hall x (List.mem_cons_self _ _)
    obtain ⟨r, er, hr⟩ := try_customer_ok hS hN hrange hact hinv hcurr hctx x0 x1 xr
    unfold customer_loop
    rw [if_neg (ne_of_gt x0), er]
    obtain ⟨st2, b⟩ := r
    cases b with
    | true => exact ⟨_, rfl, hr⟩
    | false =>
      dsimp only
      have e : s.get_next_customer_vertex x = 0 := hch
      rw [e]
      unfold customer_loop
      rw [if_pos rfl]
      exact ⟨_, rfl, hr⟩
  | cons y rest ih =>
    intro x fuel st P hch hall hf hinv hcurr hctx
    obtain ⟨f, rfl⟩ : ∃ f, fuel = f + 1 := ⟨fuel - 1, by omega⟩
    obtain ⟨x0, x1, xr⟩ := hall x (List.mem_cons_self _ _)
    obtain ⟨r, er, hr⟩ := try_customer_ok hS hN hrange hact hinv hcurr hctx x0 x1 xr
    unfold customer_loop
    rw [if_neg (ne_of_gt x0), er]
    obtain ⟨st2, b⟩ := r
    cases b with
    | true => exact ⟨_, rfl, hr⟩
    | false =>
      dsimp only
      have e : s.get_next_customer_vertex x = y := hch.1
      rw [e]
      have hr2 := hr
      obtain ⟨P2, a1, a2, a3, _⟩ := hr2
      obtain ⟨b1, b2⟩ := a3 rfl
      have a2b : st.rni ≤ st2.rni := a2
      have hPc : P2 curr = P curr := a1 curr hcurr
      obtain ⟨r3, er3, hr3⟩ := ih y f st2 P2 hch.2 (fun u hu => hall u (List.mem_cons_of_mem _ hu))
        (by simp at hf ⊢; omega) b1 (by omega)
        ⟨by rw [hPc]; exact hctx.head, by rw [hPc]; exact hctx.load⟩
      exact ⟨r3, er3, step_comp a1 a2 b2 hr3⟩

/-- The loop over the heap of nodes stops, with a feasible chain or without one. -/
theorem main_loop_ok (hS : Served I s) (hN : (I.vertices_num : Int) ≤ 2147483647)
    (hrange : ∀ m, m < mg.moves.length →
      0 ≤ (mg.get m).2 ∧ (mg.get m).2 < (I.vertices_num : Int))
    (hact : ∀ v : Int, 0 < v → v < (I.vertices_num : Int) →
      ∀ m ∈ mg.get_move_generator_indices_involving_1st v,
        m < mg.moves.length ∧ (mg.get m).1 = v)
    {fuel : Nat} (hfuel : I.vertices_num < fuel) :
    ∀ (n : Nat) (st : EjectionChain) (P : Nat → List Nat), SearchInv I mg tolerance s st P →
      st.relo_heap.size + 25 < n + st.rni →
      ∃ st3 P3, main_loop I mg tolerance s fuel n st = some st3 ∧
        Stopped I mg tolerance s st3 P3 := by
  intro n
  induction n with
  | zero =>
    intro st P hinv hm
    have := hinv.rni_lt
    omega
  | succ n ih =>
    intro st P hinv hm
    unfold main_loop
    by_cases h0 : st.relo_heap.size = 0
    · rw [if_pos h0]
      exact ⟨st, P, rfl, Or.inr ⟨hinv.infeasible, hinv.heap.linked, hinv.size_i, hinv.size_j⟩⟩
    rw [if_neg h0]
    have hpos : 0 < st.relo_heap.size := Nat.pos_of_ne_zero h0
    obtain ⟨h, eg, g1, g2, g3, g4, g5⟩ := st.relo_heap.get_ok hinv.heap hpos
    rw [eg]
    dsimp only
    unfold Solution.get_route_index
    have hcurr : st.relo_heap.heap 0 < st.rni := by
      by_contra c
      have := hinv.out _ (not_lt.1 c)
      rw [hinv.heap.linked.idx 0 hpos] at this
      omega
    have hcN := hinv.nodes _ hcurr
    have hlt := hinv.rni_lt
    have hcard := hcN.card
    have hlen := hcN.len
    obtain ⟨j0, j1⟩ := (hcN.valid _ (by rw [hcN.path]; exact List.mem_cons_self _ _)).2.1
    have hin : (s.customers_list (mg.get (st.move (st.relo_heap.heap 0))).2).route_ptr ∈
        touched mg s (P (st.relo_heap.heap 0)) := by
      rw [hcN.path]
      exact head_touched _ _
    rw [hcN.loads.read_ok (by omega) (hS.ptr _ j0 j1).1 hin]
    dsimp only
    have hupd : upd st.modified_routes_loads (st.relo_heap.heap 0)
        (st.modified_routes_loads (st.relo_heap.heap 0)) = st.modified_routes_loads := by
      funext q
      by_cases c : q = st.relo_heap.heap 0
      · rw [c, upd_same]
      · rw [upd_other _ _ _ _ c]
    rw [hupd]
    have hinv1 : SearchInv I mg tolerance s { st with relo_heap := h } P :=
      ⟨hinv.rni_lt, fun k hk => (hinv.nodes k hk).same_node rfl rfl (by show h.delta k = _; rw [g3])
        rfl rfl rfl rfl rfl rfl (fun _ => rfl), g1, fun k hk => g5 k (hinv.out k hk),
        hinv.infeasible, hinv.exact, hinv.size_i, hinv.size_j⟩
    obtain ⟨x, t, w1, w2, w3, w4⟩ := hS.walk _ j0 j1
    obtain ⟨r, er, hr⟩ := customer_loop_ok hS hN hrange hact t x fuel _ P (w1 ▸ w2) w3
      (by omega) hinv1 hcurr ⟨⟨_, _, hcN.path, rfl⟩, rfl⟩
    have ex : s.get_first_customer
        (s.customers_list (mg.get (st.move (st.relo_heap.heap 0))).2).route_ptr = x := w1
    rw [ex, er]
    obtain ⟨st3, b⟩ := r
    obtain ⟨P2, a1, a2, a3, a4⟩ := hr
    cases b with
    | true => exact ⟨st3, P2, rfl, a4 rfl⟩
    | false =>
      dsimp only
      obtain ⟨b1, b2⟩ := a3 rfl
      have b2b : st3.relo_heap.size + st.rni = h.size + st3.rni := b2
      exact ih st3 P2 b1 (by omega)

end Loops

end EjectionChain

/-! ## The root of the relocation tree -/

namespace EjectionChain

section Root

variable {I : Instance} {mg : MoveGenerators} {tolerance : Int} {s : Solution}

theorem loads_after_nil (r : Nat) : loads_after I mg s [] r = s.get_route_load r := by
  simp [loads_after, Solution.get_route_load]

/-- The statements that set up the root establish the invariant of the search: the root is
the end of the path that consists of the generating move. -/
theorem open_root_ok (hS : Served I s) (hN : (I.vertices_num : Int) ≤ 2147483647)
    {st : EjectionChain} (hready : st.Ready) (h0 : st.rni = 0) (hf : st.feasible_rni = -1)
    (hexact : ∀ m, (st.moves_heap.heap_index m ≠ -1 ∨ st.computed m = true) →
      st.moves_heap.delta m = compute_cost I mg s m)
    {g : Nat} (hg : g < mg.moves.length) (hmove : st.move 0 = g) (hI : Inter I mg s g)
    (hdelta : st.moves_heap.delta g = compute_cost I mg s g)
    (hle : st.moves_heap.delta g ≤ -tolerance) (hdem : 0 ≤ I.demand (mg.get g).1) :
    ∃ st2, open_root I s st (st.moves_heap.delta g) (s.customers_list (mg.get g).1).route_ptr
        (s.customers_list (mg.get g).2).route_ptr (s.customers_list (mg.get g).1).prev
        (mg.get g).1 (s.customers_list (mg.get g).1).next (s.customers_list (mg.get g).2).prev
        (mg.get g).2 = some st2 ∧
      SearchInv I mg tolerance s st2 (fun _ => [g]) ∧ st2.rni = 1 ∧ st2.relo_heap.size = 1 := by
  obtain ⟨ri, rj, rp, rn, rq⟩ := served_ranges hS hN hI
  obtain ⟨⟨i0, i1⟩, ⟨j0, j1⟩, hne⟩ := hI
  obtain ⟨fi0, fj0, mv0, pr0, ml0, rh0, fr0, cfe0, mh0, cp0, rni0⟩ := st
  dsimp only at h0 hf hexact hmove hdelta hle
  subst h0
  obtain ⟨hl, hsi, hsj⟩ := hready
  dsimp only at hl hsi hsj
  -- the rows
  obtain ⟨o1, o2, o3⟩ := BitMatrix.reset_row fi0 0
  obtain ⟨fi, efi, mfi, rfi, ofi⟩ := forbid_i_ok (o2.trans hsi) o1 (by simp) rp rq
  obtain ⟨p1, p2, p3⟩ := BitMatrix.reset_row fj0 0
  obtain ⟨fj, efj, mfj, rfj, ofj⟩ := forbid_j_ok (p2.trans hsj) p1 (by simp) ri rn rj
  -- the loads
  have hi0 := (hS.ptr _ i0 i1)
  have hj0 := (hS.ptr _ j0 j1)
  obtain ⟨b, eb, mb⟩ := set_loads_ok
    (SmallFlatMap.clear_ok (ml0 0) (loads_after I mg s [])) (by simp) hi0.1 hj0.1
    (s.get_route_load (s.customers_list (mg.get g).1).route_ptr - I.demand (mg.get g).1)
    (s.get_route_load (s.customers_list (mg.get g).2).route_ptr + I.demand (mg.get g).1)
  -- the heap
  obtain ⟨q1, q2, q3, q4⟩ := MGHeap.reset_linked _ (MGHeap.set_delta_linked rh0 0 (mh0.delta g) hl)
  obtain ⟨h, eh, hok, hsize, hdl, _, hidx⟩ := MGHeap.insert_ok _ 0 q1 (q3 0)
  have hloads : ∀ k, loads_after I mg s [g] k =
      upd (upd (loads_after I mg s []) (s.customers_list (mg.get g).1).route_ptr
        (s.get_route_load (s.customers_list (mg.get g).1).route_ptr - I.demand (mg.get g).1))
        (s.customers_list (mg.get g).2).route_ptr
        (s.get_route_load (s.customers_list (mg.get g).2).route_ptr + I.demand (mg.get g).1) k := by
    intro k
    rw [loads_after_step hne k, loads_after_nil, loads_after_nil]
  have hd0 : h.delta 0 = mh0.delta g := by
    rw [hdl, q4]
    exact upd_same rh0.delta 0 (mh0.delta g)
  refine ⟨{ forbidden_i := fi, forbidden_j := fj, move := mv0,
            predecessor := upd pr0 0 (-1), modified_routes_loads := upd ml0 0 b,
            relo_heap := h, feasible_rni := fr0, computed_for_ejch := cfe0, moves_heap := mh0,
            computed := cp0, rni := 0 + 1 }, ?_, ?_, rfl, by rw [hsize, q2]⟩
  · unfold open_root
    dsimp only
    rw [efi]
    dsimp only
    rw [efj]
    dsimp only
    rw [eb]
    dsimp only
    rw [eh]
  · refine ⟨by show 0 + 1 < 25; omega, fun n hn => ?_, hok, fun n hn => ?_, hf, hexact, mfi, mfj⟩
    · have hn0 : n = 0 := by
        have : n < 0 + 1 := hn
        omega
      subst hn0
      have hp0 : upd pr0 0 (-1 : Int) 0 = -1 := upd_same pr0 0 (-1)
      refine ⟨?_, Or.inl hp0, by simp, ?_, ?_, ?_, List.pairwise_singleton _ _,
        ?_, ?_, rfi, rfj, ?_, ?_⟩
      · show [g] = mv0 0 :: (if upd pr0 0 (-1) 0 = -1 then [] else _)
        rw [if_pos hp0, hmove]
      · show (insert _ (insert _ ∅) : Finset Nat).card ≤ _
        have a1 := Finset.card_insert_le (s.customers_list (mg.get g).2).route_ptr
          (insert (s.customers_list (mg.get g).1).route_ptr ∅)
        have a2 := Finset.card_insert_le (s.customers_list (mg.get g).1).route_ptr
          (∅ : Finset Nat)
        rw [Finset.card_empty] at a2
        simp only [List.length_singleton]
        omega
      · intro m hm
        rw [List.mem_singleton.1 hm]
        exact hg
      · intro m hm
        rw [List.mem_singleton.1 hm]
        exact ⟨⟨i0, i1⟩, ⟨j0, j1⟩, hne⟩
      · show h.delta 0 = _
        rw [hd0, hdelta]
        simp
      · show h.delta 0 ≤ _
        rw [hd0]
        exact hle
      · show SmallFlatMap.MapOK (upd ml0 0 b 0) _ _
        rw [upd_same]
        exact MapOK_congr mb (fun k _ => (hloads k).symm)
      · intro r hr hrj
        have hrj2 : r ≠ (s.customers_list (mg.get g).2).route_ptr := by
          have e : mv0 0 = g := hmove
          rw [← e]
          exact hrj
        rw [hloads r, upd_other _ _ _ _ hrj2]
        have hri : r = (s.customers_list (mg.get g).1).route_ptr := by
          have hr2 : r ∈ touched mg s [g] := hr
          simp only [touched, Finset.mem_insert, Finset.not_mem_empty, or_false] at hr2
          rcases hr2 with e | e
          · exact absurd e hrj2
          · exact e
        rw [hri, upd_same]
        have := hS.cap _ hi0.2
        unfold Solution.get_route_load
        omega
    · have hn1 : 0 + 1 ≤ n := hn
      exact hidx n (by omega) (q3 n)

end Root

end EjectionChain

/-! ## The ends of the routes of a complete solution -/

section EndsRep

variable {I : Instance} {s : Solution} {A : Nat → List Int}

/-- A complete solution in which every route has its depot gives the relocation of a
generating move what it reads of the ends of the routes. -/
theorem ends_of_rep (hR : Rep I s A) (hdep : ∀ r, A r ≠ [] → (0 : Int) ∈ A r)
    (hcomplete : ∀ c : Int, 0 < c → c < (I.vertices_num : Int) → ∃ r, c ∈ A r) : Ends I s := by
  have base : ∀ v : Int, 0 < v → v < (I.vertices_num : Int) → ∃ r, v ∈ A r ∧
      (s.customers_list v).route_ptr = r ∧
      s.get_prev_vertex r (s.get_next_vertex r 0) = 0 ∧
      s.get_next_vertex r (s.get_prev_vertex r 0) = 0 ∧
      s.get_next_vertex r 0 ∈ A r ∧ s.get_prev_vertex r 0 ∈ A r ∧
      s.get_next_vertex r 0 ≠ 0 ∧ s.get_next_vertex r (s.get_prev_vertex r v) = v := by
    intro v h0 h1
    obtain ⟨r, hr⟩ := hcomplete v h0 h1
    have hv0 : v ≠ 0 := by omega
    have hne : A r ≠ [] := List.ne_nil_of_mem hr
    have hc := (hR.routes r).cycle hne
    have hnx := IsCycle_next_ne hc (hR.routes r).nodup
      (two_le_length_of_mem (hdep r hne) hr hv0)
    obtain ⟨f1, f2, f3, f4, _⟩ := IsCycle_facts hc 0 (hdep r hne)
    obtain ⟨_, g2, _, _, _⟩ := IsCycle_facts hc v hr
    exact ⟨r, hr, (hR.route_of_mem hv0 hr).1, f1, f2, f3, f4, hnx 0 (hdep r hne), g2⟩
  have hz : ∀ r, s.get_next_vertex r 0 = (s.routes_list r).first_customer := fun r => by
    simp [Solution.get_next_vertex]
  have hy : ∀ r, s.get_prev_vertex r 0 = (s.routes_list r).last_customer := fun r => by
    simp [Solution.get_prev_vertex]
  refine ⟨fun v h0 h1 => ?_, fun v h0 h1 => ?_, fun v h0 h1 hp => ?_⟩
  · obtain ⟨r, hr, e, f1, f2, f3, f4, f5, _⟩ := base v h0 h1
    rw [e]
    rw [hz] at f1 f3 f5
    have hrg := (hR.routes r).range _ f3
    rw [Solution.get_prev_vertex_ne _ _ f5] at f1
    exact ⟨by omega, hrg.2, f1⟩
  · obtain ⟨r, hr, e, f1, f2, f3, f4, f5, _⟩ := base v h0 h1
    rw [e]
    rw [hy] at f2 f4
    have hrg := (hR.routes r).range _ f4
    have hl0 : (s.routes_list r).last_customer ≠ 0 := by
      intro c
      rw [c] at f2
      exact f5 f2
    rw [Solution.get_next_vertex_ne _ _ hl0] at f2
    exact ⟨by omega, hrg.2, f2, (hR.route_of_mem hl0 f4).1⟩
  · obtain ⟨r, hr, e, _, _, _, _, _, g⟩ := base v h0 h1
    rw [e]
    rw [Solution.get_prev_vertex_ne _ _ (by omega : v ≠ 0), hp, hz] at g
    exact g

end EndsRep

/-! ## The relocation of a generating move that involves the depot -/

namespace Solution

section DepotFrames

variable (I : Instance) (s : Solution) (ra : Bool) (r : Nat)

/-- The removal of the depot from a route leaves the entering arc of every vertex but the
first customer of the route as it is. -/
theorem remove_depot_prev_field (u : Int) (hu : u ≠ (s.routes_list r).first_customer) :
    ((remove_vertex I s ra r 0).1.customers_list u).prev = (s.customers_list u).prev ∧
    ((remove_vertex I s ra r 0).1.customers_list u).c_prev_curr =
      (s.customers_list u).c_prev_curr := by
  simp only [remove_vertex, if_true]
  constructor
  · simp only [set_prev_vertex_ptr, set_next_vertex_ptr]
    split_ifs <;> simp [hu]
  · simp only [set_prev_vertex_ptr, set_next_vertex_ptr]
    split_ifs <;> simp [hu]

/-- The removal of a customer that is not the last one of its route leaves the last
customer of the route and the cached cost of the arc entering the depot as they are. -/
theorem remove_vertex_last_field {v : Int} (hv : v ≠ 0) (hn : (s.customers_list v).next ≠ 0)
    (hl : v ≠ (s.routes_list r).last_customer) :
    ((remove_vertex I s ra r v).1.routes_list r).last_customer =
      (s.routes_list r).last_customer ∧
    ((remove_vertex I s ra r v).1.routes_list r).c_prev_curr = (s.routes_list r).c_prev_curr := by
  simp only [remove_vertex, hv, if_false]
  constructor
  · simp [reset_vertex, set_prev_vertex_ptr, set_next_vertex_ptr, set_cost_prev_vertex, hn, hl]
  · simp [reset_vertex, set_prev_vertex_ptr, set_next_vertex_ptr, set_cost_prev_vertex, hn, hl]

end DepotFrames

end Solution

namespace EjectionChain

section RootMove

variable {I : Instance} {s : Solution}

/-- The stored cost after the relocation of the depot to before customer `j` of a route. -/
theorem relocate_cost_first (hS : Served I s) (hE : Ends I s) {j : Int} (j0 : 0 < j)
    (j1 : j < (I.vertices_num : Int))
    (hjn : j ≠ s.get_next_vertex (s.get_route_index_fallback 0 j) 0) :
    (relocate I s 0 j).solution_cost = s.solution_cost +
      (-s.get_cost_prev_vertex (s.get_route_index_fallback 0 j) 0
        - s.get_cost_prev_vertex (s.get_route_index_fallback 0 j)
            (s.get_next_vertex (s.get_route_index_fallback 0 j) 0)
        + I.cost (s.get_prev_vertex (s.get_route_index_fallback 0 j) 0)
            (s.get_next_vertex (s.get_route_index_fallback 0 j) 0)
        - s.get_cost_prev_vertex (s.get_route_index_fallback j 0) j
        + I.cost (s.get_prev_vertex (s.get_route_index_fallback j 0) j) 0 + I.cost 0 j) := by
  have hj : j ≠ 0 := ne_of_gt j0
  have ef : s.get_route_index_fallback 0 j = (s.customers_list j).route_ptr := by
    simp [Solution.get_route_index_fallback]
  rw [ef] at hjn
  rw [ef, fallback_ne s 0 hj]
  have hz : s.get_next_vertex (s.customers_list j).route_ptr 0 =
      (s.routes_list (s.customers_list j).route_ptr).first_customer := by
    simp [Solution.get_next_vertex]
  have hy : s.get_prev_vertex (s.customers_list j).route_ptr 0 =
      (s.routes_list (s.customers_list j).route_ptr).last_customer := by
    simp [Solution.get_prev_vertex]
  rw [hz] at hjn
  obtain ⟨f0, f1, f2⟩ := hE.first j j0 j1
  obtain ⟨l0, l1, l2, l3⟩ := hE.last j j0 j1
  have hp0 : (s.customers_list j).prev ≠ 0 := fun c => hjn (hE.head j j0 j1 c).symm
  obtain ⟨a1, a2⟩ := Solution.remove_depot_prev_field I s true (s.customers_list j).route_ptr j hjn
  have h1 := Solution.remove_vertex_cost I s true (s.customers_list j).route_ptr 0
  have hpre : (Solution.remove_vertex I s true (s.customers_list j).route_ptr 0).1.InsertPre
      (s.customers_list j).route_ptr j 0 := by
    refine ⟨hj, ?_, fun _ => ⟨hj, ?_⟩⟩
    · rw [Solution.get_prev_vertex_ne _ _ hj, a1]
      exact hp0
    · rw [Solution.get_prev_vertex_ne _ _ hj, a1]
      exact hp0
  have h2 := Solution.insert_vertex_cost I
    (Solution.remove_vertex I s true (s.customers_list j).route_ptr 0).1 true
    (s.customers_list j).route_ptr j 0 hpre
  rw [Solution.get_prev_vertex_ne _ _ hj, Solution.get_cost_prev_vertex_ne _ _ hj, a1, a2, h1] at h2
  have c1 := (hS.cc _ l0 l1).2
  rw [l2, l3] at c1
  have c2 := (hS.cc _ f0 f1).1
  rw [f2] at c2
  have e : (relocate I s 0 j).solution_cost = (Solution.insert_vertex_before I
      (Solution.remove_vertex I s true (s.customers_list j).route_ptr 0).1 true
      (s.customers_list j).route_ptr j 0).solution_cost := by
    unfold relocate
    rw [ef, fallback_ne s 0 hj]
    dsimp only
    split_ifs
    · rw [(Solution.remove_route_scalars _ true _).1]
    · rfl
  rw [e, h2, Solution.get_prev_vertex_ne _ _ hj, Solution.get_cost_prev_vertex_ne _ _ hj, hz, hy,
    c1, Solution.get_cost_prev_vertex_ne _ _ (ne_of_gt f0), c2]
  ring

/-- The stored cost after the relocation of customer `i`, which is not the last one of its
route, to before the depot. -/
theorem relocate_cost_last (hS : Served I s) (hE : Ends I s) {i : Int} (i0 : 0 < i)
    (i1 : i < (I.vertices_num : Int))
    (hjn : (0 : Int) ≠ s.get_next_vertex (s.get_route_index_fallback i 0) i) :
    (relocate I s i 0).solution_cost = s.solution_cost +
      (-s.get_cost_prev_vertex (s.get_route_index_fallback i 0) i
        - s.get_cost_prev_vertex (s.get_route_index_fallback i 0)
            (s.get_next_vertex (s.get_route_index_fallback i 0) i)
        + I.cost (s.get_prev_vertex (s.get_route_index_fallback i 0) i)
            (s.get_next_vertex (s.get_route_index_fallback i 0) i)
        - s.get_cost_prev_vertex (s.get_route_index_fallback 0 i) 0
        + I.cost (s.get_prev_vertex (s.get_route_index_fallback 0 i) 0) i + I.cost i 0) := by
  have hi : i ≠ 0 := ne_of_gt i0
  have ef : s.get_route_index_fallback 0 i = (s.customers_list i).route_ptr := by
    simp [Solution.get_route_index_fallback]
  rw [fallback_ne s 0 hi, Solution.get_next_vertex_ne _ _ hi] at hjn
  rw [ef, fallback_ne s 0 hi]
  have hy : ∀ t : Solution, t.get_prev_vertex (s.customers_list i).route_ptr 0 =
      (t.routes_list (s.customers_list i).route_ptr).last_customer := fun t => by
    simp [Solution.get_prev_vertex]
  have hw : ∀ t : Solution, t.get_cost_prev_vertex (s.customers_list i).route_ptr 0 =
      (t.routes_list (s.customers_list i).route_ptr).c_prev_curr := fun t => by
    simp [Solution.get_cost_prev_vertex]
  obtain ⟨l0, l1, l2, l3⟩ := hE.last i i0 i1
  have hl : i ≠ (s.routes_list (s.customers_list i).route_ptr).last_customer := by
    intro c
    rw [← c] at l2
    exact hjn l2.symm
  obtain ⟨a1, a2⟩ := Solution.remove_vertex_last_field I s true (s.customers_list i).route_ptr hi
    (fun c => hjn c.symm) hl
  have h1 := Solution.remove_vertex_cost I s true (s.customers_list i).route_ptr i
  have hpre : (Solution.remove_vertex I s true (s.customers_list i).route_ptr i).1.InsertPre
      (s.customers_list i).route_ptr 0 i := by
    refine ⟨fun c => hi c.symm, ?_, fun c => absurd c hi⟩
    rw [hy, a1]
    exact fun c => hl c.symm
  have h2 := Solution.insert_vertex_cost I
    (Solution.remove_vertex I s true (s.customers_list i).route_ptr i).1 true
    (s.customers_list i).route_ptr 0 i hpre
  rw [hy, hw, a1, a2, h1] at h2
  obtain ⟨c1, c2⟩ := hS.cc _ i0 i1
  have e : (relocate I s i 0).solution_cost = (Solution.insert_vertex_before I
      (Solution.remove_vertex I s true (s.customers_list i).route_ptr i).1 true
      (s.customers_list i).route_ptr 0 i).solution_cost := by
    unfold relocate
    rw [ef, fallback_ne s 0 hi]
    dsimp only
    split_ifs
    · rw [(Solution.remove_route_scalars _ true _).1]
    · rfl
  rw [e, h2, hy, hw, Solution.get_prev_vertex_ne _ _ hi, Solution.get_next_vertex_ne _ _ hi,
    Solution.get_cost_prev_vertex_ne _ _ hi, c1, c2]
  ring

end RootMove

end EjectionChain

/-! ## The generating move that is feasible by itself -/

namespace EjectionChain

section Single

variable {I : Instance} {mg : MoveGenerators} {s : Solution}

/-- The relocation of a move whose second vertex is not the successor of the first changes
the stored cost by the delta of `compute_cost`, also when one of the two is the depot. -/
theorem relocate_compute (hS : Served I s) (hE : Ends I s) {g : Nat}
    (hi : 0 ≤ (mg.get g).1 ∧ (mg.get g).1 < (I.vertices_num : Int))
    (hj : 0 ≤ (mg.get g).2 ∧ (mg.get g).2 < (I.vertices_num : Int))
    (hij : (mg.get g).1 ≠ (mg.get g).2)
    (hedge : mg.get_edge_cost g = I.cost (mg.get g).1 (mg.get g).2)
    (hjn : (mg.get g).2 ≠
      s.get_next_vertex (s.get_route_index_fallback (mg.get g).1 (mg.get g).2) (mg.get g).1) :
    (relocate I s (mg.get g).1 (mg.get g).2).solution_cost =
      s.solution_cost + compute_cost I mg s g := by
  unfold compute_cost
  dsimp only
  rw [if_pos hjn, hedge]
  by_cases hi0 : (mg.get g).1 = 0
  · rw [hi0] at hjn hij ⊢
    exact relocate_cost_first hS hE (by omega) hj.2 hjn
  by_cases hj0 : (mg.get g).2 = 0
  · rw [hj0] at hjn hij ⊢
    exact relocate_cost_last hS hE (by omega) hi.2 hjn
  have i0 : 0 < (mg.get g).1 := by omega
  have j0 : 0 < (mg.get g).2 := by omega
  rw [fallback_ne s _ hi0, Solution.get_next_vertex_ne _ _ hi0] at hjn
  have hq : (s.customers_list (mg.get g).2).prev ≠ (mg.get g).1 := by
    intro c
    have := (hS.back _ j0 hj.2 (by rw [c]; exact hi0)).1
    rw [c] at this
    exact hjn this.symm
  obtain ⟨c1, c2⟩ := hS.cc _ i0 hi.2
  rw [relocate_cost I s hi0 hj0 hij hjn hq, fallback_ne s _ hi0, fallback_ne s _ hj0,
    Solution.get_prev_vertex_ne _ _ hi0, Solution.get_next_vertex_ne _ _ hi0,
    Solution.get_prev_vertex_ne _ _ hj0, Solution.get_cost_prev_vertex_ne _ _ hi0,
    Solution.get_cost_prev_vertex_ne _ _ hj0, c1, c2]
  ring

/-- The stored loads after the relocation of vertex `i` to before vertex `j`. -/
theorem relocate_load_all (I : Instance) (s : Solution) (i j : Int) (r : Nat) :
    ((relocate I s i j).routes_list r).load = (s.routes_list r).load +
      (if r = s.get_route_index_fallback j i then (if i = 0 then 0 else I.demand i) else 0) -
      (if r = s.get_route_index_fallback i j then (if i = 0 then 0 else I.demand i) else 0) := by
  have key : ∀ r2, ((Solution.insert_vertex_before I
        (Solution.remove_vertex I s true (s.get_route_index_fallback i j) i).1 true
        (s.get_route_index_fallback j i) j i).routes_list r2).load = (s.routes_list r2).load +
      (if r2 = s.get_route_index_fallback j i then (if i = 0 then 0 else I.demand i) else 0) -
      (if r2 = s.get_route_index_fallback i j then (if i = 0 then 0 else I.demand i) else 0) := by
    intro r2
    have e1 : ∀ r3, ((Solution.remove_vertex I s true (s.get_route_index_fallback i j) i).1.routes_list
        r3).load = (s.routes_list r3).load -
          (if r3 = s.get_route_index_fallback i j then (if i = 0 then 0 else I.demand i)
            else 0) := by
      intro r3
      by_cases c : r3 = s.get_route_index_fallback i j
      · rw [if_pos c, c, Solution.remove_vertex_load]
      · rw [if_neg c, Solution.remove_vertex_load_other I s true _ r3 c]
        ring
    by_cases c : r2 = s.get_route_index_fallback j i
    · rw [if_pos c, c, Solution.insert_vertex_load, e1]
      ring
    · rw [if_neg c, Solution.insert_vertex_load_other I _ true _ r2 c, e1]
      ring
  have hsame : ((relocate I s i j).routes_list r).load =
      ((Solution.insert_vertex_before I
        (Solution.remove_vertex I s true (s.get_route_index_fallback i j) i).1 true
        (s.get_route_index_fallback j i) j i).routes_list r).load := by
    unfold relocate
    dsimp only
    by_cases h1 : (Solution.insert_vertex_before I
        (Solution.remove_vertex I s true (s.get_route_index_fallback i j) i).1 true
        (s.get_route_index_fallback j i) j i).is_route_empty (s.get_route_index_fallback i j) = true
    · rw [if_pos h1, Solution.remove_route_load]
      by_cases g : r = s.get_route_index_fallback i j
      · rw [if_pos g, g]
        simp only [Solution.is_route_empty, decide_eq_true_eq] at h1
        exact h1.symm
      · rw [if_neg g]
    · rw [if_neg h1]
  rw [hsame, key]

/-- After the relocation of a generating move that passes the first test of `is_feasible`
no route of the solution is loaded beyond the capacity. -/
theorem relocate_capped (hS : Served I s) (i j : Int) (hd : 0 ≤ I.demand i)
    (hfe : s.get_route_index_fallback i j = s.get_route_index_fallback j i ∨
      s.get_route_load (s.get_route_index_fallback j i) + I.demand i ≤ I.vehicle_capacity)
    (r : Nat) (h : ((relocate I s i j).routes_list r).in_solution = true) :
    ((relocate I s i j).routes_list r).load ≤ I.vehicle_capacity := by
  have hin := relocate_in_solution I s r h
  have hc := hS.cap r hin
  rw [relocate_load_all]
  rcases hfe with e | e
  · rw [e]
    omega
  · unfold Solution.get_route_load at e
    by_cases c1 : r = s.get_route_index_fallback j i
    · rw [if_pos c1]
      rw [← c1] at e
      split_ifs <;> omega
    · rw [if_neg c1]
      split_ifs <;> omega

theorem chain_single {st : EjectionChain} (h : st.predecessor 0 = -1) :
    chain st max_relocation_nodes 0 = [st.move 0] := by
  show chain st (24 + 1) 0 = _
  unfold chain
  rw [if_neg (by decide)]
  show st.move 0 :: chain st (23 + 1) (st.predecessor 0) = _
  rw [h]
  unfold chain
  rw [if_pos rfl]

theorem execute_loop_single {st : EjectionChain} (h : st.predecessor 0 = -1) {fuel : Nat}
    (hf : 2 ≤ fuel) (t : Solution) :
    execute_loop I mg st fuel 0 t =
      some (relocate I t (mg.get (st.move 0)).1 (mg.get (st.move 0)).2) := by
  obtain ⟨f, rfl⟩ : ∃ f, fuel = f + 2 := ⟨fuel - 2, by omega⟩
  unfold execute_loop
  rw [if_neg (by decide)]
  show execute_loop I mg st (f + 1) (st.predecessor 0) _ = _
  rw [h]
  unfold execute_loop
  rw [if_pos rfl]
  rfl

end Single

end EjectionChain

/-! ## Method is_feasible and the chain it records -/

namespace EjectionChain

section Feasible

variable {I : Instance} {mg : MoveGenerators} {tolerance : Int} {s : Solution}

/-- The row entries of the branch taken when the generating move is feasible by itself are
vertices. -/
theorem root_ranges (hS : Served I s) (hE : Ends I s) {i j : Int}
    (hi : 0 ≤ i ∧ i < (I.vertices_num : Int)) (hj : 0 ≤ j ∧ j < (I.vertices_num : Int))
    (hij : i ≠ j) :
    (0 ≤ s.get_prev_vertex (s.get_route_index_fallback i j) i ∧
      s.get_prev_vertex (s.get_route_index_fallback i j) i < (I.vertices_num : Int)) ∧
    (0 ≤ s.get_next_vertex (s.get_route_index_fallback i j) i ∧
      s.get_next_vertex (s.get_route_index_fallback i j) i < (I.vertices_num : Int)) := by
  by_cases hi0 : i = 0
  · have j0 : 0 < j := by omega
    have ef : s.get_route_index_fallback i j = (s.customers_list j).route_ptr := by
      simp [Solution.get_route_index_fallback, hi0]
    obtain ⟨f0, f1, _⟩ := hE.first j j0 hj.2
    obtain ⟨l0, l1, _⟩ := hE.last j j0 hj.2
    rw [ef, hi0]
    simp only [Solution.get_prev_vertex, Solution.get_next_vertex, if_true]
    exact ⟨⟨by omega, l1⟩, ⟨by omega, f1⟩⟩
  · have i0 : 0 < i := by omega
    obtain ⟨⟨a1, a2, _⟩, ⟨a3, a4, _⟩⟩ := hS.range _ i0 hi.2
    rw [Solution.get_prev_vertex_ne _ _ hi0, Solution.get_next_vertex_ne _ _ hi0]
    exact ⟨⟨a1, a2⟩, ⟨a3, a4⟩⟩

/-- Method `is_feasible` returns, and when it returns true the chain it has recorded has at
most 25 moves with distinct first vertices, and `execute` applies their relocations: no
route of the solution is then loaded beyond the capacity and the stored cost has changed by
the sum of the deltas of the moves on the solution before the chain, which is at most
minus the tolerance. -/
theorem is_feasible_spec (hS : Served I s) (hE : Ends I s)
    (hN : (I.vertices_num : Int) ≤ 2147483647)
    (hmoves : ∀ m, m < mg.moves.length →
      (0 ≤ (mg.get m).1 ∧ (mg.get m).1 < (I.vertices_num : Int)) ∧
      (0 ≤ (mg.get m).2 ∧ (mg.get m).2 < (I.vertices_num : Int)) ∧
      (mg.get m).1 ≠ (mg.get m).2 ∧ mg.get_edge_cost m = I.cost (mg.get m).1 (mg.get m).2)
    (hact : ∀ v : Int, 0 < v → v < (I.vertices_num : Int) →
      ∀ m ∈ mg.get_move_generator_indices_involving_1st v,
        m < mg.moves.length ∧ (mg.get m).1 = v)
    {st : EjectionChain} (hready : st.Ready)
    (hexact : ∀ m, (st.moves_heap.heap_index m ≠ -1 ∨ st.computed m = true) →
      st.moves_heap.delta m = compute_cost I mg s m)
    {g : Nat} (hg : g < mg.moves.length) (hheaped : st.moves_heap.heap_index g ≠ -1)
    (hlt : st.moves_heap.delta g < -tolerance) (hdem : 0 ≤ I.demand (mg.get g).1)
    (hjn : (mg.get g).2 ≠
      s.get_next_vertex (s.get_route_index_fallback (mg.get g).1 (mg.get g).2) (mg.get g).1)
    {fuel : Nat} (hfuel : I.vertices_num < fuel) (hfuel2 : 25 < fuel) :
    ∃ b st2, is_feasible I mg tolerance fuel s st g = some (b, st2) ∧
      (b = true →
        st2.recorded.length ≤ 25 ∧ (st2.recorded.map (fun m => (mg.get m).1)).Nodup ∧
        ∃ s2, execute I mg st2 fuel s = some s2 ∧
          (∀ r, (s2.routes_list r).in_solution = true →
            (s2.routes_list r).load ≤ I.vehicle_capacity) ∧
          s2.solution_cost = s.solution_cost + (st2.recorded.map (compute_cost I mg s)).sum ∧
          (st2.recorded.map (compute_cost I mg s)).sum ≤ -tolerance) := by
  obtain ⟨gi, gj, gij, gedge⟩ := hmoves g hg
  have hdelta := hexact g (Or.inl hheaped)
  unfold is_feasible
  dsimp only
  by_cases hfe : s.get_route_index_fallback (mg.get g).1 (mg.get g).2 =
      s.get_route_index_fallback (mg.get g).2 (mg.get g).1 ∨
      s.get_route_load (s.get_route_index_fallback (mg.get g).2 (mg.get g).1) +
        I.demand (mg.get g).1 ≤ I.vehicle_capacity
  · rw [if_pos hfe]
    obtain ⟨ra, rb⟩ := root_ranges hS hE gi gj gij
    obtain ⟨rc, _⟩ := root_ranges hS hE gj gi (fun c => gij c.symm)
    obtain ⟨o1, o2, _⟩ := BitMatrix.reset_row st.forbidden_i 0
    obtain ⟨f5, e5, _⟩ := forbid_all_ok (o2.trans hready.size_i) o1 (by simp)
      (vertex_range hN ra) (vertex_range hN gi) (vertex_range hN rb) (vertex_range hN rc)
      (vertex_range hN gj)
    unfold accept_root
    dsimp only
    rw [e5]
    dsimp only
    refine ⟨true, _, rfl, fun _ => ?_⟩
    have hp : upd st.predecessor 0 (-1 : Int) 0 = -1 := upd_same _ _ _
    have hm : upd st.move 0 g 0 = g := upd_same _ _ _
    have hrec : recorded { st with rni := 0, feasible_rni := 0, move := upd st.move 0 g,
                                   predecessor := upd st.predecessor 0 (-1), forbidden_i := f5,
                                   forbidden_j := st.forbidden_j.reset 0 } = [g] := by
      unfold recorded
      dsimp only
      rw [chain_single hp]
      exact congrArg (fun x => [x]) hm
    have hexe : execute I mg { st with rni := 0, feasible_rni := 0, move := upd st.move 0 g,
                                       predecessor := upd st.predecessor 0 (-1), forbidden_i := f5,
                                       forbidden_j := st.forbidden_j.reset 0 } fuel s =
        some (relocate I s (mg.get g).1 (mg.get g).2) := by
      unfold execute
      dsimp only
      rw [execute_loop_single hp (by omega)]
      dsimp only
      rw [hm]
    have hsum : ([g].map (compute_cost I mg s)).sum = compute_cost I mg s g := by simp
    refine ⟨?_, ?_, _, hexe, ?_, ?_, ?_⟩
    · rw [hrec]
      simp
    · rw [hrec]
      simp
    · exact relocate_capped hS _ _ hdem hfe
    · rw [hrec, hsum]
      exact relocate_compute hS hE gi gj gij gedge hjn
    · rw [hrec, hsum, ← hdelta]
      exact le_of_lt hlt
  · rw [if_neg hfe]
    rw [not_or] at hfe
    obtain ⟨hne, hover⟩ := hfe
    have hi0 : (mg.get g).1 ≠ 0 := by
      intro c
      apply hne
      have hj0 : (mg.get g).2 ≠ 0 := fun d => gij (c.trans d.symm)
      simp [Solution.get_route_index_fallback, c, hj0]
    have hj0 : (mg.get g).2 ≠ 0 := by
      intro c
      apply hne
      simp [Solution.get_route_index_fallback, c, hi0]
    rw [fallback_ne s _ hi0, fallback_ne s _ hj0] at hne
    have hI : Inter I mg s g := ⟨⟨by omega, gi.2⟩, ⟨by omega, gj.2⟩, hne⟩
    rw [fallback_ne s _ hi0, fallback_ne s _ hj0, Solution.get_prev_vertex_ne _ _ hi0,
      Solution.get_next_vertex_ne _ _ hi0, Solution.get_prev_vertex_ne _ _ hj0]
    obtain ⟨st2, e2, hinv2, hr2, hs2⟩ := @open_root_ok I mg tolerance s hS hN
      { st with rni := 0, feasible_rni := -1, move := upd st.move 0 g }
      ⟨hready.linked, hready.size_i, hready.size_j⟩ rfl rfl hexact g hg (upd_same st.move 0 g) hI hdelta
      (le_of_lt hlt) hdem
    rw [e2]
    dsimp only
    obtain ⟨st3, P3, e3, hstop⟩ := main_loop_ok hS hN (fun m hm => (hmoves m hm).2.1) hact hfuel
      fuel st2 _ hinv2 (by omega)
    rw [e3]
    dsimp only
    refine ⟨_, st3, rfl, fun hb => ?_⟩
    rcases hstop with hF | ⟨hneg, _⟩
    swap
    · rw [hneg] at hb
      exact absurd hb (by decide)
    have hnodes := hF.nodes
    have hlast := hnodes st3.rni (le_refl _)
    have hlt3 := hF.rni_lt
    have hrec : recorded st3 = P3 st3.rni := by
      unfold recorded
      rw [hF.feasible]
      exact chain_eq st3.rni _ hlt3 hnodes
    have hexe : execute I mg st3 fuel s = some (run I mg (P3 st3.rni) s) := by
      unfold execute
      rw [hF.feasible]
      exact execute_loop_eq st3.rni fuel s (by omega) hnodes
    obtain ⟨q1, q2, q3⟩ := run_spec I mg s (P3 st3.rni) s
      (fun m hm => proper_of_inter hS (hlast.valid m hm))
      (pairwise_indep hS _ hlast.valid hlast.free) (fun m _ => Kept.self mg s m)
    have hbr : (List.map (bracket I mg s) (P3 st3.rni)) =
        (List.map (compute_cost I mg s) (P3 st3.rni)) :=
      List.map_congr_left (fun m hm => bracket_eq hS (hlast.valid m hm)
        (hmoves m (hlast.inside m hm)).2.2.2)
    refine ⟨?_, ?_, _, hexe, fun r hr => ?_, ?_, ?_⟩
    · rw [hrec]
      have := hlast.len
      omega
    · rw [hrec]
      exact firsts_nodup _ hlast.free
    · rw [q2 r]
      by_cases c : r ∈ touched mg s (P3 st3.rni)
      · exact hF.capped r c
      · have := loads_after_untouched (I := I) (P3 st3.rni) r c
        unfold loads_after at this
        rw [this]
        exact hS.cap r (q3 r hr)
    · rw [hrec, q1, hbr]
    · rw [hrec, ← hlast.delta]
      exact hlast.le

end Feasible

end EjectionChain

/-! ## CircleSector: overlap of two sectors -/

namespace CircleSector

/-- Static method `positive_mod` returns the residue in `[0, 65535]`. -/
theorem positive_mod_eq (i : Int) : positive_mod i = i % 65536 := by
  unfold positive_mod
  have h1 : Int.tmod i 65536 = i - 65536 * i.tdiv 65536 := Int.tmod_def i 65536
  have h2 : -65536 < Int.tmod i 65536 := by
    cases i with
    | ofNat n =>
      have := Int.tmod_nonneg (65536 : Int) (Int.ofNat_nonneg n)
      exact lt_of_lt_of_le (by decide) this
    | negSucc n =>
      show -65536 < -(((n + 1) % 65536 : Nat) : Int)
      have := Nat.mod_lt (n + 1) (by decide : 0 < 65536)
      omega
  rw [Int.tmod_eq_emod (by omega) (by decide), h1]
  omega

end CircleSector
/-! ## Order crossover -/

namespace Genetic

theorem add_mod_inj {n j a b : Nat} (ha : a < n) (hb : b < n)
    (h : (j + a) % n = (j + b) % n) : a = b := by
  have h2 : a ≡ b [MOD n] := Nat.ModEq.add_left_cancel' j h
  have h3 : a % n = b % n := h2
  rwa [Nat.mod_eq_of_lt ha, Nat.mod_eq_of_lt hb] at h3

/-- The loop that copies from parent 1 runs through `m` positions. -/
theorem copy_loop_spec (n : Nat) (p1 : Nat → Int) (end_ : Nat) :
    ∀ (m j : Nat) (result : Nat → Int) (freq : Int → Bool) (fuel : Nat), m < fuel → m ≤ n →
      (∀ t, t < m → (j + t) % n ≠ (end_ + 1) % n) → (j + m) % n = (end_ + 1) % n →
      ∃ R F, copy_loop n p1 end_ fuel j result freq = some (R, F, j + m) ∧
        (∀ t, t < m → R ((j + t) % n) = p1 ((j + t) % n)) ∧
        (∀ p, (∀ t, t < m → p ≠ (j + t) % n) → R p = result p) ∧
        (∀ v, F v = true ↔ (freq v = true ∨ ∃ t, t < m ∧ v = p1 ((j + t) % n))) := by
  intro m
  induction m with
  | zero =>
    intro j result freq fuel hf _ _ hstop
    obtain ⟨f, rfl⟩ : ∃ f, fuel = f + 1 := ⟨fuel - 1, by omega⟩
    refine ⟨result, freq, ?_, fun t ht => absurd ht (Nat.not_lt_zero t), fun _ _ => rfl,
      fun v => ⟨fun h => Or.inl h, fun h => ?_⟩⟩
    · rw [Nat.add_zero] at hstop
      unfold copy_loop
      rw [if_neg (not_not.2 hstop)]
      rfl
    · rcases h with h | ⟨t, ht, _⟩
      · exact h
      · exact absurd ht (Nat.not_lt_zero t)
  | succ m ih =>
    intro j result freq fuel hf hmn hgo hstop
    obtain ⟨f, rfl⟩ : ∃ f, fuel = f + 1 := ⟨fuel - 1, by omega⟩
    obtain ⟨R, F, e, r1, r2, r3⟩ := ih (j + 1) (upd result (j % n) (p1 (j % n)))
      (upd freq (upd result (j % n) (p1 (j % n)) (j % n)) true) f (by omega) (by omega)
      (fun t ht => by
        have := hgo (t + 1) (by omega)
        rwa [show j + (t + 1) = j + 1 + t by omega] at this)
      (by rwa [show j + (m + 1) = j + 1 + m by omega] at hstop)
    have hfirst : ∀ t, t < m → j % n ≠ (j + 1 + t) % n := by
      intro t ht c
      have := @add_mod_inj n j 0 (t + 1) (by omega) (by omega)
        (by rw [Nat.add_zero, c]; congr 1; omega)
      omega
    refine ⟨R, F, ?_, fun t ht => ?_, fun p hp => ?_, fun v => ?_⟩
    · unfold copy_loop
      rw [if_pos (by have := hgo 0 (by omega); rwa [Nat.add_zero] at this)]
      dsimp only
      rw [e]
      congr 3
      omega
    · rcases Nat.eq_zero_or_pos t with h0 | h0
      · rw [h0, Nat.add_zero, r2 _ hfirst, upd_same]
      · have := r1 (t - 1) (by omega)
        rwa [show j + 1 + (t - 1) = j + t by omega] at this
    · rw [r2 p (fun t ht => by
        have := hp (t + 1) (by omega)
        rwa [show j + (t + 1) = j + 1 + t by omega] at this)]
      exact upd_other _ _ _ _ (by have := hp 0 (by omega); rwa [Nat.add_zero] at this)
    · rw [r3 v, upd_same]
      constructor
      · rintro (h | ⟨t, ht, e2⟩)
        · by_cases c : v = p1 (j % n)
          · exact Or.inr ⟨0, by omega, by rw [Nat.add_zero]; exact c⟩
          · rw [upd_other _ _ _ _ c] at h
            exact Or.inl h
        · exact Or.inr ⟨t + 1, by omega, by rw [show j + (t + 1) = j + 1 + t by omega]; exact e2⟩
      · rintro (h | ⟨t, ht, e2⟩)
        · left
          by_cases c : v = p1 (j % n)
          · rw [c, upd_same]
          · rw [upd_other _ _ _ _ c]
            exact h
        · rcases Nat.eq_zero_or_pos t with h0 | h0
          · left
            rw [h0, Nat.add_zero] at e2
            rw [e2, upd_same]
          · exact Or.inr ⟨t - 1, by omega, by
              rw [show j + 1 + (t - 1) = j + t by omega]; exact e2⟩

/-- The loop that fills from parent 2 writes the values that are not marked, in their
order, into the positions that follow `j`. -/
theorem fill_loop_spec (n : Nat) (p2 : Nat → Int) (end_ : Nat) (F : Int → Bool) :
    ∀ (l : List Nat) (acc : (Nat → Int) × Nat),
      ((l.map (fun i => p2 ((end_ + i) % n))).filter (fun v => !F v)).length ≤ n →
      (l.foldl (fill_step n p2 end_ F) acc).2 =
        acc.2 + ((l.map (fun i => p2 ((end_ + i) % n))).filter (fun v => !F v)).length ∧
      (∀ r, r < ((l.map (fun i => p2 ((end_ + i) % n))).filter (fun v => !F v)).length →
        (l.foldl (fill_step n p2 end_ F) acc).1 ((acc.2 + r) % n) =
          ((l.map (fun i => p2 ((end_ + i) % n))).filter (fun v => !F v)).getD r 0) ∧
      (∀ p, (∀ r, r < ((l.map (fun i => p2 ((end_ + i) % n))).filter (fun v => !F v)).length →
          p ≠ (acc.2 + r) % n) →
        (l.foldl (fill_step n p2 end_ F) acc).1 p = acc.1 p) := by
  intro l
  induction l with
  | nil =>
    intro acc _
    exact ⟨rfl, fun r hr => absurd hr (Nat.not_lt_zero r), fun _ _ => rfl⟩
  | cons i rest ih =>
    intro acc hlen
    rw [List.map_cons] at hlen
    rw [List.foldl_cons, List.map_cons]
    by_cases c : F (p2 ((end_ + i) % n)) = false
    · have hk : List.filter (fun v => !F v) (p2 ((end_ + i) % n) ::
          rest.map (fun i => p2 ((end_ + i) % n))) =
          p2 ((end_ + i) % n) ::
            (rest.map (fun i => p2 ((end_ + i) % n))).filter (fun v => !F v) := by
        rw [List.filter_cons, if_pos (by rw [c]; rfl)]
      rw [hk] at hlen ⊢
      rw [List.length_cons] at hlen ⊢
      have hstep : fill_step n p2 end_ F acc i =
          (upd acc.1 (acc.2 % n) (p2 ((end_ + i) % n)), acc.2 + 1) := by
        unfold fill_step
        rw [if_pos c]
      rw [hstep]
      obtain ⟨a1, a2, a3⟩ := ih (upd acc.1 (acc.2 % n) (p2 ((end_ + i) % n)), acc.2 + 1)
        (by omega)
      refine ⟨by rw [a1]; dsimp only; omega, fun r hr => ?_, fun p hp => ?_⟩
      · rcases Nat.eq_zero_or_pos r with h0 | h0
        · subst h0
          rw [List.getD_cons_zero, a3]
          · exact upd_same _ _ _
          intro r2 hr2 e
          have := @add_mod_inj n acc.2 0 (r2 + 1) (by omega) (by omega)
            (by rw [e]; dsimp only; congr 1; omega)
          omega
        · obtain ⟨q, rfl⟩ : ∃ q, r = q + 1 := ⟨r - 1, by omega⟩
          rw [List.getD_cons_succ, ← a2 q (by omega)]
          dsimp only
          rw [show acc.2 + (q + 1) = acc.2 + 1 + q by omega]
      · rw [a3 p (fun r hr e => hp (r + 1) (by omega) (by
          rw [e]; dsimp only; congr 1; omega))]
        exact upd_other _ _ _ _ (by have := hp 0 (by omega); rwa [Nat.add_zero] at this)
    · have hk : List.filter (fun v => !F v) (p2 ((end_ + i) % n) ::
          rest.map (fun i => p2 ((end_ + i) % n))) =
          (rest.map (fun i => p2 ((end_ + i) % n))).filter (fun v => !F v) := by
        have ct : F (p2 ((end_ + i) % n)) = true := by
          cases h : F (p2 ((end_ + i) % n))
          · exact absurd h c
          · rfl
        rw [List.filter_cons, if_neg (by rw [ct]; simp)]
      rw [hk] at hlen ⊢
      have hstep : fill_step n p2 end_ F acc i = acc := by
        unfold fill_step
        rw [if_neg c]
      rw [hstep]
      exact ih acc hlen

end Genetic
namespace Genetic

theorem rot_perm {α : Type} (n a : Nat) (f : Nat → α) :
    ((List.range n).map (fun i => f ((a + i) % n))).Perm ((List.range n).map f) := by
  have e : (List.range n).map (fun i => (a + i) % n) = (List.range n).rotate a := by
    apply List.ext_getElem
    · simp
    · intro i h1 h2
      rw [List.getElem_map, List.getElem_range, List.getElem_rotate, List.getElem_range,
        List.length_range, Nat.add_comm]
  have : (List.range n).map (fun i => f ((a + i) % n)) =
      ((List.range n).map (fun i => (a + i) % n)).map f := by
    rw [List.map_map]
    rfl
  rw [this, e]
  exact (List.rotate_perm _ _).map f

theorem list_eq_of_getD (K : List Int) (f : Nat → Int) (m : Nat) (hm : K.length = m)
    (h : ∀ r, r < m → f r = K.getD r 0) : (List.range m).map f = K := by
  apply List.ext_getElem
  · simp [hm]
  · intro i h1 h2
    rw [List.getElem_map, List.getElem_range, h i (by rw [← hm]; exact h2),
      List.getD_eq_getElem _ _ h2]

theorem tour_list_nodup (n : Nat) : ((List.range n).map (fun (i : Nat) => (i : Int) + 1)).Nodup := by
  have hinj : Function.Injective (fun i : Nat => (i : Int) + 1) := by
    intro a b h
    have : (a : Int) + 1 = (b : Int) + 1 := h
    omega
  exact List.Nodup.map hinj (List.nodup_range n)

theorem range_split (n c : Nat) (hc : c ≤ n) (g : Nat → Int) :
    (List.range n).map g =
      (List.range c).map g ++ (List.range (n - c)).map (fun r => g (c + r)) := by
  have := List.range_add c (n - c)
  rw [show c + (n - c) = n by omega] at this
  rw [this, List.map_append, List.map_map]
  rfl

theorem IsTour.nodup {n : Nat} {p : Nat → Int} (h : IsTour n p) :
    ((List.range n).map p).Nodup :=
  (List.Perm.nodup_iff h).2 (tour_list_nodup n)

theorem IsTour.inj {n : Nat} {p : Nat → Int} (h : IsTour n p) {a b : Nat} (ha : a < n)
    (hb : b < n) (e : p a = p b) : a = b :=
  List.inj_on_of_nodup_map h.nodup (List.mem_range.2 ha) (List.mem_range.2 hb) e

theorem IsTour.tour_mem {n : Nat} {p : Nat → Int} (h : IsTour n p) {a : Nat} (ha : a < n) :
    p a ∈ (List.range n).map (fun (i : Nat) => (i : Int) + 1) :=
  (List.Perm.mem_iff h).1 (List.mem_map.2 ⟨a, List.mem_range.2 ha, rfl⟩)

/-- The result of the order crossover, for a copied range of `c < n` positions. -/
theorem crossoverOX_core (n : Nat) (p1 p2 res0 : Nat → Int) (h1 : IsTour n p1)
    (h2 : IsTour n p2) (start end_ c : Nat) (hc : c < n)
    (hstop : (start + c) % n = (end_ + 1) % n) (fuel : Nat) (hf : n < fuel) :
    ∃ res, crossoverOX n res0 p1 p2 start end_ fuel = some res ∧ IsTour n res ∧
      (∀ t, t < c → res ((start + t) % n) = p1 ((start + t) % n)) ∧
      (List.range (n - c)).map (fun r => res ((end_ + 1 + r) % n)) =
        ((List.range n).map (fun i => p2 ((end_ + 1 + i) % n))).filter
          (fun v => decide (v ∉ (List.range c).map (fun t => p1 ((start + t) % n)))) := by
  have hgo : ∀ t, t < c → (start + t) % n ≠ (end_ + 1) % n := by
    intro t ht e
    have := @add_mod_inj n start t c (by omega) hc (by rw [e, hstop])
    omega
  obtain ⟨R, F, e1, r1, r2, r3⟩ := copy_loop_spec n p1 end_ c start res0 (fun _ => false) fuel
    (by omega) (by omega) hgo hstop
  have hF : ∀ v, F v = true ↔ v ∈ (List.range c).map (fun t => p1 ((start + t) % n)) := by
    intro v
    rw [r3 v, List.mem_map]
    constructor
    · rintro (h | ⟨t, ht, e⟩)
      · exact absurd h Bool.false_ne_true
      · exact ⟨t, List.mem_range.2 ht, e.symm⟩
    · rintro ⟨t, ht, e⟩
      exact Or.inr ⟨t, List.mem_range.1 ht, e.symm⟩
  -- the values of parent 2 in the order of the second loop
  have hC2 : ((List.range n).map (fun i => i + 1)).map (fun i => p2 ((end_ + i) % n)) =
      (List.range n).map (fun i => p2 ((end_ + 1 + i) % n)) := by
    rw [List.map_map]
    apply List.map_congr_left
    intro i _
    show p2 ((end_ + (i + 1)) % n) = _
    rw [show end_ + (i + 1) = end_ + 1 + i by omega]
  have hC2perm : ((List.range n).map (fun i => p2 ((end_ + 1 + i) % n))).Perm
      ((List.range n).map (fun (i : Nat) => (i : Int) + 1)) := (rot_perm n (end_ + 1) p2).trans h2
  have hC2nd : ((List.range n).map (fun i => p2 ((end_ + 1 + i) % n))).Nodup :=
    (List.Perm.nodup_iff hC2perm).2 (tour_list_nodup n)
  have hSnd : ((List.range c).map (fun t => p1 ((start + t) % n))).Nodup := by
    apply List.Nodup.map_on _ (List.nodup_range c)
    intro a ha b hb e
    have := h1.inj (Nat.mod_lt _ (by omega)) (Nat.mod_lt _ (by omega)) e
    exact add_mod_inj (by have := List.mem_range.1 ha; omega)
      (by have := List.mem_range.1 hb; omega) this
  have hSsub : ∀ v, v ∈ (List.range c).map (fun t => p1 ((start + t) % n)) →
      v ∈ (List.range n).map (fun i => p2 ((end_ + 1 + i) % n)) := by
    intro v hv
    obtain ⟨t, _, rfl⟩ := List.mem_map.1 hv
    exact (List.Perm.mem_iff hC2perm).2 (h1.tour_mem (Nat.mod_lt _ (by omega)))
  have hKin : (((List.range n).map (fun i => p2 ((end_ + 1 + i) % n))).filter
      (fun v => F v)).Perm ((List.range c).map (fun t => p1 ((start + t) % n))) := by
    rw [List.perm_ext_iff_of_nodup (hC2nd.filter _) hSnd]
    intro v
    rw [List.mem_filter]
    constructor
    · rintro ⟨_, h⟩
      exact (hF v).1 h
    · intro h
      exact ⟨hSsub v h, (hF v).2 h⟩
  have hsplit := List.filter_append_perm (fun v => F v)
    ((List.range n).map (fun i => p2 ((end_ + 1 + i) % n)))
  have hKlen : (((List.range n).map (fun i => p2 ((end_ + 1 + i) % n))).filter
      (fun v => !F v)).length = n - c := by
    have a := hsplit.length_eq
    have b := hKin.length_eq
    rw [List.length_append, b] at a
    simp only [List.length_map, List.length_range] at a
    omega
  have hfill := fill_loop_spec n p2 end_ F ((List.range n).map (fun i => i + 1)) (R, start + c)
    (by rw [hC2, hKlen]; omega)
  rw [hC2, hKlen] at hfill
  obtain ⟨_, f2, f3⟩ := hfill
  have hres : crossoverOX n res0 p1 p2 start end_ fuel =
      some (((List.range n).map (fun i => i + 1)).foldl (fill_step n p2 end_ F)
        (R, start + c)).1 := by
    unfold crossoverOX
    rw [e1]
  have hpred : ∀ v, (!F v) =
      decide (v ∉ (List.range c).map (fun t => p1 ((start + t) % n))) := by
    intro v
    by_cases hv : v ∈ (List.range c).map (fun t => p1 ((start + t) % n))
    · rw [(hF v).2 hv, decide_eq_false (not_not.2 hv)]
      rfl
    · have : F v = false := by
        cases h : F v
        · rfl
        · exact absurd ((hF v).1 h) hv
      rw [this, decide_eq_true hv]
      rfl
  have hKeq : ((List.range n).map (fun i => p2 ((end_ + 1 + i) % n))).filter (fun v => !F v) =
      ((List.range n).map (fun i => p2 ((end_ + 1 + i) % n))).filter
        (fun v => decide (v ∉ (List.range c).map (fun t => p1 ((start + t) % n)))) :=
    List.filter_congr (fun v _ => hpred v)
  have hpos : ∀ r, (start + c + r) % n = (end_ + 1 + r) % n := by
    intro r
    rw [Nat.add_mod, hstop, ← Nat.add_mod]
  have hcopy : ∀ t, t < c →
      (((List.range n).map (fun i => i + 1)).foldl (fill_step n p2 end_ F) (R, start + c)).1
        ((start + t) % n) = p1 ((start + t) % n) := by
    intro t ht
    rw [f3 _ (fun r hr e => by
      have := @add_mod_inj n start t (c + r) (by omega) (by omega)
        (by rw [e]; dsimp only; congr 1; omega)
      omega)]
    exact r1 t ht
  have hrest : (List.range (n - c)).map (fun r =>
      (((List.range n).map (fun i => i + 1)).foldl (fill_step n p2 end_ F) (R, start + c)).1
        ((end_ + 1 + r) % n)) =
      ((List.range n).map (fun i => p2 ((end_ + 1 + i) % n))).filter (fun v => !F v) := by
    apply list_eq_of_getD _ _ _ hKlen
    intro r hr
    rw [← f2 r hr]
    dsimp only
    rw [hpos]
  refine ⟨_, hres, ?_, hcopy, by rw [← hKeq]; exact hrest⟩
  -- the result is a permutation
  have hrot := rot_perm n start
    (((List.range n).map (fun i => i + 1)).foldl (fill_step n p2 end_ F) (R, start + c)).1
  refine hrot.symm.trans ?_
  have hn : n = c + (n - c) := by omega
  have hlist : (List.range n).map (fun i =>
      (((List.range n).map (fun i => i + 1)).foldl (fill_step n p2 end_ F) (R, start + c)).1
        ((start + i) % n)) =
      (List.range c).map (fun t => p1 ((start + t) % n)) ++
        ((List.range n).map (fun i => p2 ((end_ + 1 + i) % n))).filter (fun v => !F v) := by
    rw [range_split n c (by omega)]
    congr 1
    · apply List.map_congr_left
      intro t ht
      exact hcopy t (List.mem_range.1 ht)
    · rw [← hrest]
      apply List.map_congr_left
      intro r _
      show (((List.range n).map (fun i => i + 1)).foldl (fill_step n p2 end_ F)
        (R, start + c)).1 ((start + (c + r)) % n) = _
      rw [← hpos, Nat.add_assoc]
  rw [hlist]
  exact ((hKin.symm.append_right _).trans hsplit).trans hC2perm

end Genetic
/-! ## The drivers of the local search -/

namespace VariableNeighborhoodDescentComposer

/-- One pass through the tiers, each of which returns, keeps the invariant `P` and does not
raise the cost: the pass returns, keeps `P`, does not raise the cost, and it is left by the
`goto` only with a cost that is lower by more than the tolerance. -/
theorem tiers_loop_spec (tolerance : ℚ) (P : Solution → Prop) :
    ∀ (tiers : List (Solution → Option Solution)) (n : Nat) (s : Solution),
      (∀ tier ∈ tiers, ∀ s, P s → ∃ s2, tier s = some s2 ∧ P s2 ∧ s2.get_cost ≤ s.get_cost) →
      P s →
      ∃ s2 b, tiers_loop tolerance n tiers s = some (s2, b) ∧ P s2 ∧
        s2.get_cost ≤ s.get_cost ∧
        (b = true → (s2.get_cost : ℚ) + tolerance < (s.get_cost : ℚ)) := by
  intro tiers
  induction tiers with
  | nil =>
    intro n s _ hP
    exact ⟨s, false, rfl, hP, le_refl _, fun h => absurd h Bool.false_ne_true⟩
  | cons tier rest ih =>
    intro n s h hP
    obtain ⟨s1, e1, P1, c1⟩ := h tier (List.mem_cons_self _ _) s hP
    by_cases c : n > 0 ∧ (s1.get_cost : ℚ) + tolerance < (s.get_cost : ℚ)
    · refine ⟨s1, true, ?_, P1, c1, fun _ => c.2⟩
      unfold tiers_loop
      simp only [e1]
      rw [if_pos c]
    · obtain ⟨s2, b, e2, P2, c2, hb⟩ := ih (n + 1) s1
        (fun t ht => h t (List.mem_cons_of_mem _ ht)) P1
      refine ⟨s2, b, ?_, P2, le_trans c2 c1, fun hb2 => ?_⟩
      · unfold tiers_loop
        simp only [e1]
        rw [if_neg c]
        exact e2
      · have := hb hb2
        have c1q : (s1.get_cost : ℚ) ≤ (s.get_cost : ℚ) := by exact_mod_cast c1
        linarith

/-- With a positive tolerance and tiers that return, keep an invariant `P` under which the
cost is not negative, and do not raise the cost, `sequential_apply` returns as soon as the
fuel times the tolerance exceeds the cost; the restarts times the tolerance do not exceed
the decrease of the cost, and the last pass was not left by the `goto`. -/
theorem sequential_apply_spec (tolerance : ℚ) (htol : 0 < tolerance) (P : Solution → Prop)
    (tiers : List (Solution → Option Solution))
    (h : ∀ tier ∈ tiers, ∀ s, P s → ∃ s2, tier s = some s2 ∧ P s2 ∧ s2.get_cost ≤ s.get_cost)
    (hnn : ∀ s, P s → 0 ≤ s.get_cost) :
    ∀ (fuel : Nat) (s : Solution), P s → (s.get_cost : ℚ) < (fuel : ℚ) * tolerance →
      ∃ s2 k, sequential_apply tolerance tiers fuel s = some (s2, k) ∧ P s2 ∧
        s2.get_cost ≤ s.get_cost ∧
        (k : ℚ) * tolerance ≤ (s.get_cost : ℚ) - (s2.get_cost : ℚ) ∧
        ∃ s1, tiers_loop tolerance 0 tiers s1 = some (s2, false) := by
  intro fuel
  induction fuel with
  | zero =>
    intro s hP hlt
    have := hnn s hP
    simp at hlt
    omega
  | succ f ih =>
    intro s hP hlt
    obtain ⟨s1, b, e1, P1, c1, hb⟩ := tiers_loop_spec tolerance P tiers 0 s h hP
    cases b with
    | false =>
      refine ⟨s1, 0, ?_, P1, c1, ?_, s, e1⟩
      · unfold sequential_apply
        simp only [e1]
      · simp
        exact c1
    | true =>
      have hdrop := hb rfl
      have hlt2 : (s1.get_cost : ℚ) < (f : ℚ) * tolerance := by
        push_cast at hlt
        linarith
      obtain ⟨s2, k, e2, P2, c2, hk, hlast⟩ := ih s1 P1 hlt2
      refine ⟨s2, k + 1, ?_, P2, le_trans c2 c1, ?_, hlast⟩
      · unfold sequential_apply
        simp only [e1, e2, Option.map_some']
      · push_cast
        linarith

/-- Whenever `sequential_apply` returns, its last pass through the tiers was not left by
the `goto`. -/
theorem sequential_apply_last (tolerance : ℚ) (tiers : List (Solution → Option Solution)) :
    ∀ (fuel : Nat) (s s2 : Solution) (k : Nat),
      sequential_apply tolerance tiers fuel s = some (s2, k) →
      ∃ s1, tiers_loop tolerance 0 tiers s1 = some (s2, false) := by
  intro fuel
  induction fuel with
  | zero =>
    intro s s2 k e
    exact absurd e (by simp [sequential_apply])
  | succ f ih =>
    intro s s2 k e
    unfold sequential_apply at e
    cases h1 : tiers_loop tolerance 0 tiers s with
    | none => simp [h1] at e
    | some r =>
      obtain ⟨s1, b⟩ := r
      cases b with
      | false =>
        simp [h1] at e
        exact ⟨s, by rw [h1, e.1]⟩
      | true =>
        simp only [h1] at e
        cases h2 : sequential_apply tolerance tiers f s1 with
        | none => simp [h2] at e
        | some r2 =>
          obtain ⟨s3, k3⟩ := r2
          simp [h2] at e
          exact ih s1 s3 k3 (by rw [h2]) |>.imp (fun s0 hs0 => by rw [hs0, e.1])

end VariableNeighborhoodDescentComposer

namespace RandomizedVariableNeighborhoodDescent

/-- The loop of `apply` over operators that return: the log grows by the operators, in
their order. -/
theorem apply_loop_log (run : Nat → Solution → Option Solution)
    (hrun : ∀ op s, ∃ s2, run op s = some s2) :
    ∀ (ops : List Nat) (s : Solution) (log : List Nat),
      ∃ s2, ops.foldlM (fun (acc : Solution × List Nat) op =>
        (run op acc.1).map (fun s2 => (s2, acc.2 ++ [op]))) (s, log) = some (s2, log ++ ops) := by
  intro ops
  induction ops with
  | nil =>
    intro s log
    exact ⟨s, by simp⟩
  | cons op rest ih =>
    intro s log
    obtain ⟨s1, e1⟩ := hrun op s
    obtain ⟨s2, e2⟩ := ih s1 (log ++ [op])
    refine ⟨s2, ?_⟩
    rw [List.foldlM_cons]
    simp only [e1, Option.map_some', Option.bind_eq_bind, Option.some_bind]
    rw [e2]
    simp

end RandomizedVariableNeighborhoodDescent

theorem costOperator_spec (a b : Int) (hb : 0 ≤ b) (hab : b ≤ a) (s : Solution)
    (hs : 0 ≤ s.get_cost) :
    ∃ s2, costOperator a b s = some s2 ∧ 0 ≤ s2.get_cost ∧ s2.get_cost ≤ s.get_cost := by
  unfold costOperator
  by_cases c : s.get_cost = a
  · rw [if_pos c]
    refine ⟨_, rfl, ?_, ?_⟩
    · show 0 ≤ s.solution_cost + (b - a)
      have : s.solution_cost = a := c
      omega
    · show s.solution_cost + (b - a) ≤ s.solution_cost
      omega
  · rw [if_neg c]
    exact ⟨s, rfl, hs, le_refl _⟩

theorem costOperators_return (op : Nat) (s : Solution) : ∃ s2, costOperators op s = some s2 := by
  have h : ∀ a b, ∃ s2, costOperator a b s = some s2 := by
    intro a b
    unfold costOperator
    by_cases c : s.get_cost = a
    · rw [if_pos c]
      exact ⟨_, rfl⟩
    · rw [if_neg c]
      exact ⟨_, rfl⟩
  unfold costOperators
  by_cases c : op = 0
  · rw [if_pos c]
    exact h 8 7
  · rw [if_neg c]
    exact h 10 8
/-! ## The initialization phase of the local search -/

namespace MoveGenerators

theorem twin_twin (idx : Nat) :
    get_twin_move_generator_index (get_twin_move_generator_index idx) = idx := by
  unfold get_twin_move_generator_index
  rw [Nat.xor_assoc, Nat.xor_self, Nat.xor_zero]

theorem twin_odd (m : Nat) : get_twin_move_generator_index (2 * m + 1) = 2 * m := by
  rw [← twin_even, twin_twin]

theorem twin_cases (idx : Nat) :
    (idx % 2 = 0 ∧ get_twin_move_generator_index idx = idx + 1) ∨
    (idx % 2 = 1 ∧ get_twin_move_generator_index idx = idx - 1) := by
  rcases Nat.mod_two_eq_zero_or_one idx with h | h
  · left
    refine ⟨h, ?_⟩
    have e : idx = 2 * (idx / 2) := by omega
    rw [e, twin_even]
  · right
    refine ⟨h, ?_⟩
    have e : idx = 2 * (idx / 2) + 1 := by omega
    rw [e, twin_odd]
    omega

theorem twin_ne (idx : Nat) : get_twin_move_generator_index idx ≠ idx := by
  rcases twin_cases idx with ⟨h, e⟩ | ⟨h, e⟩ <;> rw [e] <;> omega

theorem twin_inj {a b : Nat}
    (h : get_twin_move_generator_index a = get_twin_move_generator_index b) : a = b := by
  have := congrArg get_twin_move_generator_index h
  rwa [twin_twin, twin_twin] at this

theorem twin_half (idx : Nat) : get_twin_move_generator_index idx / 2 = idx / 2 := by
  rcases twin_cases idx with ⟨h, e⟩ | ⟨h, e⟩ <;> rw [e] <;> omega

theorem base_cases (idx : Nat) :
    get_base_move_generator_index idx = idx ∨
    get_base_move_generator_index idx = get_twin_move_generator_index idx := by
  unfold get_base_move_generator_index
  rcases twin_cases idx with ⟨h, e⟩ | ⟨h, e⟩
  · left
    omega
  · right
    rw [e]
    omega

end MoveGenerators

/-- The registries reached by calls of `set_active_percentage` have the properties that the
local search relies on. -/
theorem ActiveReach.lists {I : Instance} {nb : Int → List Int} {k : Nat}
    (hnb : NbOK I nb (min k (I.vertices_num - 1))) (hsym : CostSym I) {mg : MoveGenerators}
    {num : Int → Nat} (h : ActiveReach I nb k mg num) : mg.Lists := by
  obtain ⟨hsame, hact⟩ := h.active_ok hnb hsym
  have hP := (MoveGenerators.create_inv hnb hsym).same hsame
  have hpair : ∀ idx, idx < mg.size →
      mg.get (MoveGenerators.get_twin_move_generator_index idx) =
        ((mg.get idx).2, (mg.get idx).1) ∧
      MoveGenerators.get_twin_move_generator_index idx < mg.size ∧
      (mg.get idx).1 ≠ (mg.get idx).2 := by
    intro idx hidx
    rcases MoveGenerators.twin_cases idx with ⟨hp, e⟩ | ⟨hp, e⟩
    · have e2 : idx = 2 * (idx / 2) := by omega
      obtain ⟨t1, t2, t3⟩ := hP.twin (m := idx / 2) (by omega)
      have e3 : 2 * (idx / 2) + 1 = idx + 1 := by omega
      rw [e3] at t2 t3
      rw [← e2] at t1 t2
      rw [e]
      exact ⟨t2, t3, ne_of_lt t1⟩
    · have e2 : idx = 2 * (idx / 2) + 1 := by omega
      obtain ⟨t1, t2, t3⟩ := hP.twin (m := idx / 2) (by omega)
      rw [← e2] at t2
      rw [e]
      have e3 : idx - 1 = 2 * (idx / 2) := by omega
      rw [e3, t2]
      exact ⟨rfl, by omega, fun c => (ne_of_lt t1) c.symm⟩
  refine ⟨fun idx h => (hpair idx h).1, fun idx h => (hpair idx h).2.1,
    fun idx h => (hpair idx h).2.2, fun v idx hin => ?_, fun v => ?_, fun v idx hin => ?_⟩
  · rw [hact.lists v] at hin
    obtain ⟨a, b, _⟩ := (hP.mem_oriented v idx).1 hin
    exact ⟨a, b⟩
  · rw [hact.lists v]
    exact List.Nodup.of_map _ (hP.oriented_nodup v)
  · rw [hact.lists v] at hin
    rw [hact.lists]
    obtain ⟨a, b, c⟩ := (hP.mem_oriented v idx).1 hin
    refine (hP.mem_oriented _ _).2 ⟨(hpair idx a).2.1, ?_, ?_⟩
    · rw [(hpair idx a).1]
    · unfold MoveGenerators.is_active_in_any at c ⊢
      rw [MoveGenerators.twin_half]
      exact c

namespace CommonOperator

theorem SameFrame.frame_refl (st : CommonOperator) : SameFrame st st := ⟨rfl, rfl, rfl, rfl⟩

theorem SameFrame.frame_trans {a b c : CommonOperator} (h1 : SameFrame a b)
    (h2 : SameFrame b c) : SameFrame a c :=
  ⟨h1.1.trans h2.1, h1.2.1.trans h2.2.1, h1.2.2.1.trans h2.2.2.1, h1.2.2.2.trans h2.2.2.2⟩

theorem InitInv.widen {mg : MoveGenerators} {G : Nat → Int → Prop} {tolerance : Int}
    {ct : Nat} {st : CommonOperator} {pre q : List Nat} (h : InitInv mg G tolerance ct st pre) (hpre : ∀ x ∈ pre, x ∈ q) :
    InitInv mg G tolerance ct st q :=
  ⟨h.heap_ok, h.ev_nodup, h.ins_nodup, h.ins_sub, h.unheaped, h.in_range, fun m hm => by
    rcases h.covered m hm with c | c | ⟨idx, hin, c⟩
    · exact Or.inl c
    · exact Or.inr (Or.inl c)
    · exact Or.inr (Or.inr ⟨idx, hpre idx hin, c⟩), h.vals, h.lows⟩

/-- The statements of the initialization for a move that has not been evaluated yet: they
return, the invariant is kept, and the move has been added to the log. -/
theorem init_move_inv {mg : MoveGenerators} {G : Nat → Int → Prop} {ct : Nat}
    {st : CommonOperator} {pre q : List Nat} (tolerance : Int) (hI : InitInv mg G tolerance ct st pre) (m : Nat) (d : Int)
    (hm : m ∉ st.evaluated) (hlt : m < mg.size) (hpre : ∀ x ∈ pre, x ∈ q)
    (hcov : st.vertex_timestamp (mg.get m).1 = ct ∨ st.vertex_timestamp (mg.get m).2 = ct ∨
      ∃ idx ∈ q, m = idx ∨ m = MoveGenerators.get_twin_move_generator_index idx)
    (hG : G m d) :
    ∃ st2, init_move tolerance st m d = some st2 ∧ InitInv mg G tolerance ct st2 q ∧
      SameFrame st2 st ∧ st2.evaluated = st.evaluated ++ [m] := by
  have h0 : st.heap.heap_index m = -1 := hI.unheaped m hm
  have e1 : (st.heap.set_delta m d).set_idx m (-1) = st.heap.set_delta m d := by
    unfold MGHeap.set_idx MGHeap.set_delta
    congr 1
    funext x
    unfold upd
    by_cases c : x = m
    · rw [if_pos c, c, h0]
    · rw [if_neg c]
  have ok1 : (st.heap.set_delta m d).OK := MGHeap.set_delta_ok st.heap m d hI.heap_ok h0
  have hd : (st.heap.set_delta m d).delta m = d := by
    show upd st.heap.delta m d m = d
    exact upd_same _ _ _
  have hmono := hI.widen hpre
  have hev : (st.evaluated ++ [m]).Nodup := by
    rw [List.nodup_append]
    refine ⟨hI.ev_nodup, List.nodup_singleton m, ?_⟩
    intro a ha hb
    rw [List.mem_singleton] at hb
    exact hm (hb ▸ ha)
  have hcovered : ∀ x ∈ st.evaluated ++ [m],
      st.vertex_timestamp (mg.get x).1 = ct ∨ st.vertex_timestamp (mg.get x).2 = ct ∨
      ∃ idx ∈ q, x = idx ∨ x = MoveGenerators.get_twin_move_generator_index idx := by
    intro x hx
    rcases List.mem_append.1 hx with h | h
    · exact hmono.covered x h
    · rw [List.mem_singleton] at h
      rw [h]
      exact hcov
  have hrange : ∀ x ∈ st.evaluated ++ [m], x < mg.size := by
    intro x hx
    rcases List.mem_append.1 hx with h | h
    · exact hI.in_range x h
    · rw [List.mem_singleton] at h
      rw [h]
      exact hlt
  have hvals : ∀ x ∈ st.evaluated ++ [m], G x (upd st.heap.delta m d x) := by
    intro x hx
    rcases List.mem_append.1 hx with h | h
    · have hxm : x ≠ m := fun e => hm (e ▸ h)
      rw [upd_other _ _ _ _ hxm]
      exact hI.vals x h
    · rw [List.mem_singleton] at h
      rw [h, upd_same]
      exact hG
  have hlows : ∀ x, x ≠ m → st.heap.heap_index x ≠ -1 →
      upd st.heap.delta m d x < -tolerance := by
    intro x hxm hx
    rw [upd_other _ _ _ _ hxm]
    exact hI.lows x hx
  unfold init_move
  simp only [e1, hd]
  by_cases c : d < -tolerance
  · rw [if_pos c]
    obtain ⟨h2, i1, i2, _, i4, _, i6⟩ := MGHeap.insert_ok (st.heap.set_delta m d) m ok1 h0
    rw [i1]
    have i4b : h2.delta = upd st.heap.delta m d := i4
    refine ⟨_, rfl, ⟨i2, hev, ?_, ?_, ?_, hrange, hcovered, ?_, ?_⟩, ⟨rfl, rfl, rfl, rfl⟩,
      rfl⟩
    · show (st.inserted ++ [m]).Nodup
      rw [List.nodup_append]
      refine ⟨hI.ins_nodup, List.nodup_singleton m, ?_⟩
      intro a ha hb
      rw [List.mem_singleton] at hb
      exact hm (hI.ins_sub _ (hb ▸ ha))
    · intro x hx
      have hx2 : x ∈ st.inserted ++ [m] := hx
      show x ∈ st.evaluated ++ [m]
      rcases List.mem_append.1 hx2 with h | h
      · exact List.mem_append_left _ (hI.ins_sub x h)
      · exact List.mem_append_right _ h
    · intro x hx
      have hx2 : x ∉ st.evaluated ++ [m] := hx
      have hxm : x ≠ m := fun e => hx2 (List.mem_append_right _ (by rw [e]; simp))
      exact i6 x hxm (hI.unheaped x (fun h => hx2 (List.mem_append_left _ h)))
    · intro x hx
      show G x (h2.delta x)
      rw [i4b]
      exact hvals x hx
    · intro x hx
      have hx2 : h2.heap_index x ≠ -1 := hx
      show h2.delta x < -tolerance
      rw [i4b]
      by_cases hxm : x = m
      · rw [hxm, upd_same]
        exact c
      · exact hlows x hxm (fun h => hx2 (i6 x hxm h))
  · rw [if_neg c]
    refine ⟨_, rfl, ⟨ok1, hev, hI.ins_nodup, ?_, ?_, hrange, hcovered, hvals, ?_⟩,
      ⟨rfl, rfl, rfl, rfl⟩, rfl⟩
    · intro x hx
      exact List.mem_append_left _ (hI.ins_sub x hx)
    · intro x hx
      have hx2 : x ∉ st.evaluated ++ [m] := hx
      exact hI.unheaped x (fun h => hx2 (List.mem_append_left _ h))
    · intro x hx
      have hx2 : st.heap.heap_index x ≠ -1 := hx
      exact hlows x (fun e => hx2 (e ▸ h0)) hx2

/-- A move of the active list of the current vertex `i` that the inner loop has not visited
yet and whose second endpoint does not carry the timestamp: neither the move nor its twin has
been evaluated. -/
theorem InitInv.fresh {mg : MoveGenerators} (hL : mg.Lists) {G : Nat → Int → Prop}
    {tolerance : Int} {ct : Nat} {st : CommonOperator} {pre : List Nat} (hI : InitInv mg G tolerance ct st pre) {i : Int} {idx : Nat}
    (hi : st.vertex_timestamp i ≠ ct)
    (hin : idx ∈ mg.active_move_indices_involving_1st i) (hnot : idx ∉ pre)
    (hpre : ∀ x ∈ pre, x ∈ mg.active_move_indices_involving_1st i)
    (hj : st.vertex_timestamp (mg.get idx).2 ≠ ct) :
    idx ∉ st.evaluated ∧ MoveGenerators.get_twin_move_generator_index idx ∉ st.evaluated := by
  obtain ⟨hlt, hfst⟩ := hL.mem i idx hin
  have htw := hL.twin_get idx hlt
  have hne := hL.ne idx hlt
  constructor
  · intro hev
    rcases hI.covered idx hev with c | c | ⟨x, hx, c | c⟩
    · rw [hfst] at c
      exact hi c
    · exact hj c
    · exact hnot (c ▸ hx)
    · obtain ⟨xlt, xfst⟩ := hL.mem i x (hpre x hx)
      have := hL.twin_get x xlt
      rw [← c] at this
      have h1 : (mg.get idx).1 = (mg.get x).2 := congrArg Prod.fst this
      exact hL.ne x xlt (xfst.trans (hfst.symm.trans h1))
  · intro hev
    rcases hI.covered _ hev with c | c | ⟨x, hx, c | c⟩
    · rw [htw] at c
      exact hj c
    · rw [htw, hfst] at c
      exact hi c
    · obtain ⟨xlt, xfst⟩ := hL.mem i x (hpre x hx)
      rw [← c, htw] at xfst
      exact hne (hfst.trans xfst.symm)
    · exact hnot ((MoveGenerators.twin_inj c) ▸ hx)

/-- The statements of `asymmetric_init` for a move and its twin, neither of which has been
evaluated. -/
theorem init_pair_inv {mg : MoveGenerators} (hL : mg.Lists) {G : Nat → Int → Prop}
    {ct : Nat} {st : CommonOperator} {pre : List Nat} (tolerance : Int) (hI : InitInv mg G tolerance ct st pre) (idx : Nat) (d : Int × Int)
    (hlt : idx < mg.size) (h1 : idx ∉ st.evaluated)
    (h2 : MoveGenerators.get_twin_move_generator_index idx ∉ st.evaluated)
    (hG : G idx d.1 ∧ G (MoveGenerators.get_twin_move_generator_index idx) d.2) :
    ∃ st2, init_pair tolerance st idx d = some st2 ∧ InitInv mg G tolerance ct st2 (pre ++ [idx]) ∧
      SameFrame st2 st := by
  obtain ⟨st1, e1, I1, F1, ev1⟩ := init_move_inv (q := pre ++ [idx]) tolerance hI idx d.1 h1
    hlt (fun x hx => List.mem_append_left _ hx)
    (Or.inr (Or.inr ⟨idx, by simp, Or.inl rfl⟩)) hG.1
  have h2b : MoveGenerators.get_twin_move_generator_index idx ∉ st1.evaluated := by
    rw [ev1]
    intro h
    rcases List.mem_append.1 h with h | h
    · exact h2 h
    · rw [List.mem_singleton] at h
      exact MoveGenerators.twin_ne idx h
  obtain ⟨st2, e2, I2, F2, _⟩ := init_move_inv (q := pre ++ [idx]) tolerance I1
    (MoveGenerators.get_twin_move_generator_index idx) d.2 h2b (hL.twin_lt idx hlt)
    (fun x hx => hx) (Or.inr (Or.inr ⟨idx, by simp, Or.inr rfl⟩)) hG.2
  refine ⟨st2, ?_, I2, F2.frame_trans F1⟩
  unfold init_pair
  rw [e1]
  exact e2

section Steps

variable {K12 K1 K2 : Type} (T : AbstractOperator K12 K1 K2) {mg : MoveGenerators}
  (hL : mg.Lists) {G : Nat → Int → Prop} (tolerance : Int) (handle_partial_solutions : Bool)
  (s : Solution) {ct : Nat}
include hL

theorem asymmetric_init_step_ok (i : Int) (icache : K12)
    (hG : ∀ idx ∈ mg.active_move_indices_involving_1st i,
      G idx (T.compute_cost_pair idx icache
        (if (mg.get idx).2 = 0 then T.prepare_cache12_backup s (mg.get idx).2 i
          else T.prepare_cache12 s (mg.get idx).2)).1 ∧
      G (MoveGenerators.get_twin_move_generator_index idx) (T.compute_cost_pair idx icache
        (if (mg.get idx).2 = 0 then T.prepare_cache12_backup s (mg.get idx).2 i
          else T.prepare_cache12 s (mg.get idx).2)).2) :
    StepOK mg G tolerance ct i
      (asymmetric_init_step T mg tolerance handle_partial_solutions s ct i icache) := by
  intro st pre idx hI hi hin hnot hpre
  have hmono := hI.widen (q := pre ++ [idx]) (fun x hx => List.mem_append_left _ hx)
  unfold asymmetric_init_step
  dsimp only
  by_cases c1 : (handle_partial_solutions && !s.is_vertex_in_solution (mg.get idx).2) = true
  · rw [if_pos c1]
    exact ⟨st, rfl, hmono, SameFrame.frame_refl st⟩
  · rw [if_neg c1]
    by_cases c2 : st.vertex_timestamp (mg.get idx).2 = ct
    · rw [if_pos c2]
      exact ⟨st, rfl, hmono, SameFrame.frame_refl st⟩
    · rw [if_neg c2]
      obtain ⟨f1, f2⟩ := hI.fresh hL hi hin hnot hpre c2
      exact init_pair_inv hL tolerance hI idx _ (hL.mem i idx hin).1 f1 f2 (hG idx hin)

theorem asymmetric_init_depot_step_ok (i : Int)
    (hG : ∀ idx ∈ mg.active_move_indices_involving_1st i,
      G idx (T.compute_cost_pair idx (T.prepare_cache12_backup s i (mg.get idx).2)
        (T.prepare_cache12 s (mg.get idx).2)).1 ∧
      G (MoveGenerators.get_twin_move_generator_index idx) (T.compute_cost_pair idx
        (T.prepare_cache12_backup s i (mg.get idx).2) (T.prepare_cache12 s (mg.get idx).2)).2) :
    StepOK mg G tolerance ct i
      (asymmetric_init_depot_step T mg tolerance handle_partial_solutions s ct i) := by
  intro st pre idx hI hi hin hnot hpre
  have hmono := hI.widen (q := pre ++ [idx]) (fun x hx => List.mem_append_left _ hx)
  unfold asymmetric_init_depot_step
  dsimp only
  by_cases c1 : (handle_partial_solutions && !s.is_vertex_in_solution (mg.get idx).2) = true
  · rw [if_pos c1]
    exact ⟨st, rfl, hmono, SameFrame.frame_refl st⟩
  · rw [if_neg c1]
    by_cases c2 : st.vertex_timestamp (mg.get idx).2 = ct
    · rw [if_pos c2]
      exact ⟨st, rfl, hmono, SameFrame.frame_refl st⟩
    · rw [if_neg c2]
      obtain ⟨f1, f2⟩ := hI.fresh hL hi hin hnot hpre c2
      exact init_pair_inv hL tolerance hI idx _ (hL.mem i idx hin).1 f1 f2 (hG idx hin)

/-- The statements of `symmetric_init` for the base move of a move that has not been
visited. -/
theorem init_base_inv {st : CommonOperator} {pre : List Nat} (hI : InitInv mg G tolerance ct st pre)
    {i : Int} {idx : Nat} (hi : st.vertex_timestamp i ≠ ct)
    (hin : idx ∈ mg.active_move_indices_involving_1st i) (hnot : idx ∉ pre)
    (hpre : ∀ x ∈ pre, x ∈ mg.active_move_indices_involving_1st i)
    (c2 : st.vertex_timestamp (mg.get idx).2 ≠ ct) (d : Int)
    (hG : G (MoveGenerators.get_base_move_generator_index idx) d) :
    ∃ st2, init_move tolerance st (MoveGenerators.get_base_move_generator_index idx) d =
        some st2 ∧ InitInv mg G tolerance ct st2 (pre ++ [idx]) ∧ SameFrame st2 st := by
  obtain ⟨f1, f2⟩ := hI.fresh hL hi hin hnot hpre c2
  have hlt := (hL.mem i idx hin).1
  rcases MoveGenerators.base_cases idx with e | e
  · rw [e] at hG ⊢
    obtain ⟨st2, e2, I2, F2, _⟩ := init_move_inv (q := pre ++ [idx]) tolerance hI idx d f1
      hlt (fun x hx => List.mem_append_left _ hx)
      (Or.inr (Or.inr ⟨idx, by simp, Or.inl rfl⟩)) hG
    exact ⟨st2, e2, I2, F2⟩
  · rw [e] at hG ⊢
    obtain ⟨st2, e2, I2, F2, _⟩ := init_move_inv (q := pre ++ [idx]) tolerance hI _ d f2
      (hL.twin_lt idx hlt) (fun x hx => List.mem_append_left _ hx)
      (Or.inr (Or.inr ⟨idx, by simp, Or.inr rfl⟩)) hG
    exact ⟨st2, e2, I2, F2⟩

theorem symmetric_init_step_ok (i : Int) (icache : K12)
    (hG : ∀ idx ∈ mg.active_move_indices_involving_1st i,
      G (MoveGenerators.get_base_move_generator_index idx)
        (T.compute_cost_12_12 (MoveGenerators.get_base_move_generator_index idx) icache
          (if (mg.get idx).2 = 0 then T.prepare_cache12_backup s (mg.get idx).2 i
            else T.prepare_cache12 s (mg.get idx).2))) :
    StepOK mg G tolerance ct i
      (symmetric_init_step T mg tolerance handle_partial_solutions s ct i icache) := by
  intro st pre idx hI hi hin hnot hpre
  have hmono := hI.widen (q := pre ++ [idx]) (fun x hx => List.mem_append_left _ hx)
  unfold symmetric_init_step
  dsimp only
  by_cases c1 : (handle_partial_solutions && !s.is_vertex_in_solution (mg.get idx).2) = true
  · rw [if_pos c1]
    exact ⟨st, rfl, hmono, SameFrame.frame_refl st⟩
  · rw [if_neg c1]
    by_cases c2 : st.vertex_timestamp (mg.get idx).2 = ct
    · rw [if_pos c2]
      exact ⟨st, rfl, hmono, SameFrame.frame_refl st⟩
    · rw [if_neg c2]
      exact init_base_inv hL tolerance hI hi hin hnot hpre c2 _ (hG idx hin)

theorem symmetric_init_depot_step_ok (i : Int)
    (hG : ∀ idx ∈ mg.active_move_indices_involving_1st i,
      G (MoveGenerators.get_base_move_generator_index idx)
        (T.compute_cost_12_12 (MoveGenerators.get_base_move_generator_index idx)
          (T.prepare_cache12_backup s i (mg.get idx).2) (T.prepare_cache12 s (mg.get idx).2))) :
    StepOK mg G tolerance ct i
      (symmetric_init_depot_step T mg tolerance handle_partial_solutions s ct i) := by
  intro st pre idx hI hi hin hnot hpre
  have hmono := hI.widen (q := pre ++ [idx]) (fun x hx => List.mem_append_left _ hx)
  unfold symmetric_init_depot_step
  dsimp only
  by_cases c1 : (handle_partial_solutions && !s.is_vertex_in_solution (mg.get idx).2) = true
  · rw [if_pos c1]
    exact ⟨st, rfl, hmono, SameFrame.frame_refl st⟩
  · rw [if_neg c1]
    by_cases c2 : st.vertex_timestamp (mg.get idx).2 = ct
    · rw [if_pos c2]
      exact ⟨st, rfl, hmono, SameFrame.frame_refl st⟩
    · rw [if_neg c2]
      exact init_base_inv hL tolerance hI hi hin hnot hpre c2 _ (hG idx hin)

end Steps

/-- An inner loop of an initialization over the rest of the active list of the current
vertex. -/
theorem init_fold {mg : MoveGenerators} {G : Nat → Int → Prop} {tolerance : Int} {ct : Nat}
    {i : Int}
    {step : CommonOperator → Nat → Option CommonOperator} (hstep : StepOK mg G tolerance ct i step) :
    ∀ (rest pre : List Nat) (st : CommonOperator), InitInv mg G tolerance ct st pre →
      st.vertex_timestamp i ≠ ct → (pre ++ rest).Nodup →
      (∀ x ∈ pre ++ rest, x ∈ mg.active_move_indices_involving_1st i) →
      ∃ st2, rest.foldlM step st = some st2 ∧ InitInv mg G tolerance ct st2 (pre ++ rest) ∧
        SameFrame st2 st := by
  intro rest
  induction rest with
  | nil =>
    intro pre st hI _ _ _
    exact ⟨st, rfl, by rw [List.append_nil]; exact hI, SameFrame.frame_refl st⟩
  | cons idx rest ih =>
    intro pre st hI hi hnd hall
    have hnot : idx ∉ pre := by
      intro h
      have := (List.nodup_append.1 hnd).2.2
      exact this h (List.mem_cons_self _ _)
    obtain ⟨st1, e1, I1, F1⟩ := hstep st pre idx hI hi (hall idx (by simp)) hnot
      (fun x hx => hall x (List.mem_append_left _ hx))
    have hassoc : pre ++ [idx] ++ rest = pre ++ idx :: rest := by simp
    obtain ⟨st2, e2, I2, F2⟩ := ih (pre ++ [idx]) st1 I1 (by rw [F1.1]; exact hi)
      (by rw [hassoc]; exact hnd) (by rw [hassoc]; exact hall)
    refine ⟨st2, ?_, by rw [← hassoc]; exact I2, F2.frame_trans F1⟩
    rw [List.foldlM_cons, e1]
    exact e2

/-- After the inner loop of the vertex `i`, which is then stamped, every move evaluated has
an endpoint with the timestamp. -/
theorem InitInv.stamped {mg : MoveGenerators} (hL : mg.Lists) {G : Nat → Int → Prop}
    {tolerance : Int} {ct : Nat} {st : CommonOperator} {pre : List Nat} (hI : InitInv mg G tolerance ct st pre) (i : Int)
    (hpre : ∀ x ∈ pre, x ∈ mg.active_move_indices_involving_1st i) :
    InitInv mg G tolerance ct (st.stamp i ct) [] := by
  refine ⟨hI.heap_ok, hI.ev_nodup, hI.ins_nodup, hI.ins_sub, hI.unheaped, hI.in_range, ?_,
    hI.vals, hI.lows⟩
  intro m hm
  have key : ∀ v, st.vertex_timestamp v = ct ∨ v = i → (st.stamp i ct).vertex_timestamp v = ct := by
    intro v hv
    show upd st.vertex_timestamp i ct v = ct
    by_cases c : v = i
    · rw [c, upd_same]
    · rw [upd_other _ _ _ _ c]
      rcases hv with h | h
      · exact h
      · exact absurd h c
  rcases hI.covered m hm with c | c | ⟨idx, hin, c | c⟩
  · exact Or.inl (key _ (Or.inl c))
  · exact Or.inr (Or.inl (key _ (Or.inl c)))
  · rw [c]
    exact Or.inl (key _ (Or.inr (hL.mem i idx (hpre idx hin)).2))
  · rw [c, hL.twin_get idx (hL.mem i idx (hpre idx hin)).1]
    exact Or.inr (Or.inl (key _ (Or.inr (hL.mem i idx (hpre idx hin)).2)))

end CommonOperator
namespace CommonOperator

theorem SameRest.rest_refl (st : CommonOperator) : SameRest st st := ⟨rfl, rfl, rfl⟩

theorem SameRest.rest_trans {a b c : CommonOperator} (h1 : SameRest a b) (h2 : SameRest b c) :
    SameRest a c :=
  ⟨h1.1.trans h2.1, h1.2.1.trans h2.2.1, h1.2.2.trans h2.2.2⟩

theorem SameFrame.rest {a b : CommonOperator} (h : SameFrame a b) : SameRest a b :=
  ⟨h.2.1, h.2.2.1, h.2.2.2⟩

theorem OuterInv.extend {mg : MoveGenerators} {G : Nat → Int → Prop} {tolerance : Int}
    {ct : Nat} {st : CommonOperator} {done q : List Int} (h : OuterInv mg G tolerance ct st done) (hq : ∀ x ∈ done, x ∈ q) :
    OuterInv mg G tolerance ct st q :=
  ⟨h.1, fun v hv => ⟨hq v (h.2.1 v hv).1, (h.2.1 v hv).2⟩, h.2.2⟩

/-- The inner loop of a vertex `i` that has not been visited, followed by its stamp. -/
theorem inner_stamp {mg : MoveGenerators} (hL : mg.Lists) {G : Nat → Int → Prop}
    {tolerance : Int} {ct : Nat} {i : Int}
    {step : CommonOperator → Nat → Option CommonOperator} (hstep : StepOK mg G tolerance ct i step)
    {st : CommonOperator} {done : List Int} (hO : OuterInv mg G tolerance ct st done) (hi : i ∉ done)
    (hi0 : i ≠ 0) :
    ∃ st2, (mg.get_move_generator_indices_involving_1st i).foldlM step st = some st2 ∧
      OuterInv mg G tolerance ct (st2.stamp i ct) (done ++ [i]) ∧ SameRest (st2.stamp i ct) st := by
  have hvt : st.vertex_timestamp i ≠ ct := fun h => hi (hO.2.1 i h).1
  obtain ⟨st2, e2, I2, F2⟩ := init_fold hstep (mg.active_move_indices_involving_1st i) [] st
    hO.1 hvt (by rw [List.nil_append]; exact hL.nodup i) (fun x hx => by simpa using hx)
  rw [List.nil_append] at I2
  refine ⟨st2, e2, ⟨I2.stamped hL i (fun x hx => hx), fun v hv => ?_, fun v => ?_⟩,
    ⟨F2.2.1, F2.2.2.1, F2.2.2.2⟩⟩
  · have hv2 : upd st2.vertex_timestamp i ct v = ct := hv
    by_cases c : v = i
    · rw [c]
      exact ⟨by simp, hi0⟩
    · rw [upd_other _ _ _ _ c, F2.1] at hv2
      exact ⟨List.mem_append_left _ (hO.2.1 v hv2).1, (hO.2.1 v hv2).2⟩
  · show upd st2.vertex_timestamp i ct v ≤ ct
    by_cases c : v = i
    · rw [c, upd_same]
    · rw [upd_other _ _ _ _ c, F2.1]
      exact hO.2.2 v

/-- The loop of an initialization over the rest of the SVC. -/
theorem outer_fold {mg : MoveGenerators} {G : Nat → Int → Prop} {tolerance : Int} {ct : Nat}
    {f : CommonOperator × Bool → Int → Option (CommonOperator × Bool)}
    (hf : ∀ (acc : CommonOperator × Bool) (done : List Int) (i : Int),
      OuterInv mg G tolerance ct acc.1 done → i ∉ done →
      ∃ acc2, f acc i = some acc2 ∧ OuterInv mg G tolerance ct acc2.1 (done ++ [i]) ∧
        SameRest acc2.1 acc.1) :
    ∀ (rest done : List Int) (acc : CommonOperator × Bool), OuterInv mg G tolerance ct acc.1 done →
      (done ++ rest).Nodup →
      ∃ acc2, rest.foldlM f acc = some acc2 ∧ OuterInv mg G tolerance ct acc2.1 (done ++ rest) ∧
        SameRest acc2.1 acc.1 := by
  intro rest
  induction rest with
  | nil =>
    intro done acc hO _
    exact ⟨acc, rfl, by rw [List.append_nil]; exact hO, SameRest.rest_refl _⟩
  | cons i rest ih =>
    intro done acc hO hnd
    have hnot : i ∉ done := by
      intro h
      exact (List.nodup_append.1 hnd).2.2 h (List.mem_cons_self _ _)
    obtain ⟨acc1, e1, O1, R1⟩ := hf acc done i hO hnot
    have hassoc : done ++ [i] ++ rest = done ++ i :: rest := by simp
    obtain ⟨acc2, e2, O2, R2⟩ := ih (done ++ [i]) acc1 O1 (by rw [hassoc]; exact hnd)
    refine ⟨acc2, ?_, by rw [← hassoc]; exact O2, R2.rest_trans R1⟩
    rw [List.foldlM_cons, e1]
    exact e2

section Vertices

variable {K12 K1 K2 : Type} (T : AbstractOperator K12 K1 K2) {mg : MoveGenerators}
  (hL : mg.Lists) {G : Nat → Int → Prop} (tolerance : Int) (handle_partial_solutions : Bool)
  (s : Solution) {ct : Nat}
include hL

theorem asymmetric_init_vertex_ok (hG : PairExact T mg s G) (acc : CommonOperator × Bool)
    (done : List Int) (i : Int) (hO : OuterInv mg G tolerance ct acc.1 done) (hi : i ∉ done) :
    ∃ acc2, asymmetric_init_vertex T mg tolerance handle_partial_solutions s ct acc i =
        some acc2 ∧ OuterInv mg G tolerance ct acc2.1 (done ++ [i]) ∧ SameRest acc2.1 acc.1 := by
  have hmono := hO.extend (q := done ++ [i]) (fun x hx => List.mem_append_left _ hx)
  unfold asymmetric_init_vertex
  by_cases c1 : (handle_partial_solutions && !s.is_vertex_in_solution i) = true
  · rw [if_pos c1]
    exact ⟨acc, rfl, hmono, SameRest.rest_refl _⟩
  · rw [if_neg c1]
    by_cases c2 : i = 0
    · rw [if_pos c2]
      exact ⟨(acc.1, true), rfl, hmono, SameRest.rest_refl _⟩
    · rw [if_neg c2]
      obtain ⟨st2, e2, O2, R2⟩ := inner_stamp hL
        (asymmetric_init_step_ok T hL tolerance handle_partial_solutions s i
          (T.prepare_cache12 s i) (fun idx hin => hG.1 i idx c2 hin)) hO hi c2
      dsimp only
      rw [e2]
      exact ⟨_, rfl, O2, R2⟩

theorem symmetric_init_vertex_ok (hG : BaseExact T mg s G) (acc : CommonOperator × Bool)
    (done : List Int) (i : Int) (hO : OuterInv mg G tolerance ct acc.1 done) (hi : i ∉ done) :
    ∃ acc2, symmetric_init_vertex T mg tolerance handle_partial_solutions s ct acc i =
        some acc2 ∧ OuterInv mg G tolerance ct acc2.1 (done ++ [i]) ∧ SameRest acc2.1 acc.1 := by
  have hmono := hO.extend (q := done ++ [i]) (fun x hx => List.mem_append_left _ hx)
  unfold symmetric_init_vertex
  by_cases c1 : (handle_partial_solutions && !s.is_vertex_in_solution i) = true
  · rw [if_pos c1]
    exact ⟨acc, rfl, hmono, SameRest.rest_refl _⟩
  · rw [if_neg c1]
    by_cases c2 : i = 0
    · rw [if_pos c2]
      exact ⟨(acc.1, true), rfl, hmono, SameRest.rest_refl _⟩
    · rw [if_neg c2]
      obtain ⟨st2, e2, O2, R2⟩ := inner_stamp hL
        (symmetric_init_step_ok T hL tolerance handle_partial_solutions s i
          (T.prepare_cache12 s i) (fun idx hin => hG.1 i idx c2 hin)) hO hi c2
      dsimp only
      rw [e2]
      exact ⟨_, rfl, O2, R2⟩

/-- The part of an initialization for the depot, and the increment of the timestamp
generator. -/
theorem init_finish {step : CommonOperator → Nat → Option CommonOperator}
    (hstep : StepOK mg G tolerance ct 0 step) {st1 : CommonOperator} {done : List Int} (depot : Bool)
    (hO : OuterInv mg G tolerance ct st1 done) :
    ∃ st2, (if depot = true then
        ((mg.get_move_generator_indices_involving_1st 0).foldlM step st1).map
          (fun st2 => (st2.stamp 0 ct).increment)
        else some st1.increment) = some st2 ∧
      InitInv mg G tolerance ct st2 [] ∧ (∀ v, st2.vertex_timestamp v ≤ ct) ∧
      st2.timegen = st1.timegen + 1 ∧ st2.update_bits = st1.update_bits ∧
      st2.affected_vertices = st1.affected_vertices := by
  by_cases c : depot = true
  · rw [if_pos c]
    have hvt : st1.vertex_timestamp 0 ≠ ct := fun h => (hO.2.1 0 h).2 rfl
    obtain ⟨st2, e2, I2, F2⟩ := init_fold hstep (mg.active_move_indices_involving_1st 0) []
      st1 hO.1 hvt (by rw [List.nil_append]; exact hL.nodup 0) (fun x hx => by simpa using hx)
    rw [List.nil_append] at I2
    have e3 : (mg.get_move_generator_indices_involving_1st 0).foldlM step st1 = some st2 := e2
    rw [e3]
    have I3 := I2.stamped hL 0 (fun x hx => hx)
    refine ⟨_, rfl, ⟨I3.heap_ok, I3.ev_nodup, I3.ins_nodup, I3.ins_sub, I3.unheaped,
      I3.in_range, I3.covered, I3.vals, I3.lows⟩, fun v => ?_, ?_, F2.2.2.1, F2.2.2.2⟩
    · show upd st2.vertex_timestamp 0 ct v ≤ ct
      by_cases c : v = 0
      · rw [c, upd_same]
      · rw [upd_other _ _ _ _ c, F2.1]
        exact hO.2.2 v
    · show st2.timegen + 1 = st1.timegen + 1
      rw [F2.2.1]
  · rw [if_neg c]
    exact ⟨_, rfl, ⟨hO.1.heap_ok, hO.1.ev_nodup, hO.1.ins_nodup, hO.1.ins_sub, hO.1.unheaped,
      hO.1.in_range, hO.1.covered, hO.1.vals, hO.1.lows⟩, hO.2.2, rfl, rfl, rfl⟩

end Vertices

/-- The state from which an initialization starts: the heap has been reset, the logs are
empty and no timestamp exceeds the value of the timestamp generator. -/
theorem OuterInv.at_start {mg : MoveGenerators} {G : Nat → Int → Prop} {tolerance : Int}
    {st : CommonOperator} (hheap : st.heap.OK)
    (hempty : ∀ m, st.heap.heap_index m = -1) (hts : ∀ v, st.vertex_timestamp v ≤ st.timegen)
    (hev : st.evaluated = []) (hins : st.inserted = []) :
    OuterInv mg G tolerance (st.timegen + 1) st [] := by
  have hno : ∀ m, m ∉ st.evaluated := fun m hm => by
    rw [hev] at hm
    exact List.not_mem_nil m hm
  have hno2 : ∀ m, m ∉ st.inserted := fun m hm => by
    rw [hins] at hm
    exact List.not_mem_nil m hm
  refine ⟨⟨hheap, (by rw [hev]; exact List.nodup_nil), (by rw [hins]; exact List.nodup_nil),
    (fun m hm => absurd hm (hno2 m)), (fun m _ => hempty m),
    (fun m hm => absurd hm (hno m)), (fun m hm => absurd hm (hno m)),
    (fun m hm => absurd hm (hno m)), (fun m hm => absurd (hempty m) hm)⟩,
    fun v hv => ?_, fun v => Nat.le_succ_of_le (hts v)⟩
  have := hts v
  omega

section Phases

variable {K12 K1 K2 : Type} (T : AbstractOperator K12 K1 K2) {mg : MoveGenerators}
  (hL : mg.Lists) {G : Nat → Int → Prop} (tolerance : Int) (handle_partial_solutions : Bool)
  (s : Solution)
include hL

/-- Method `asymmetric_init` returns and leaves the invariant of the initialization. -/
theorem asymmetric_init_ok (hG : PairExact T mg s G) (svc : List Int) (hsvc : s.cache.Holds svc) (fuel : Nat)
    (hfuel : svc.length < fuel) (st : CommonOperator) (hheap : st.heap.OK)
    (hempty : ∀ m, st.heap.heap_index m = -1) (hts : ∀ v, st.vertex_timestamp v ≤ st.timegen)
    (hev : st.evaluated = []) (hins : st.inserted = []) :
    ∃ st2, asymmetric_init T mg tolerance handle_partial_solutions s fuel st = some st2 ∧
      InitInv mg G tolerance (st.timegen + 1) st2 [] ∧ (∀ v, st2.vertex_timestamp v ≤ st2.timegen) ∧
      st2.timegen = st.timegen + 1 ∧ st2.update_bits = st.update_bits ∧
      st2.affected_vertices = st.affected_vertices := by
  have hit : s.cache.iterate fuel s.get_svc_begin = some svc :=
    LRUCache.iterate_holds s.cache svc fuel hsvc hfuel
  obtain ⟨acc1, e1, O1, R1⟩ := outer_fold
    (asymmetric_init_vertex_ok T hL tolerance handle_partial_solutions s hG) svc []
    (st, false)
    (OuterInv.at_start hheap hempty hts hev hins)
    (by rw [List.nil_append]; exact hsvc.links.nodup)
  obtain ⟨st1, depot⟩ := acc1
  obtain ⟨st2, e2, I2, t2, g2, u2, a2⟩ := init_finish hL tolerance
    (asymmetric_init_depot_step_ok T hL tolerance handle_partial_solutions s 0 hG.2) depot
    O1
  have R1' : st1.timegen = st.timegen ∧ st1.update_bits = st.update_bits ∧
      st1.affected_vertices = st.affected_vertices := R1
  refine ⟨st2, ?_, I2, fun v => by rw [g2, R1'.1]; exact t2 v, by rw [g2, R1'.1],
    by rw [u2, R1'.2.1], by rw [a2, R1'.2.2]⟩
  unfold asymmetric_init
  simp only [hit, e1]
  exact e2

/-- Method `symmetric_init` returns and leaves the invariant of the initialization. -/
theorem symmetric_init_ok (hG : BaseExact T mg s G) (svc : List Int) (hsvc : s.cache.Holds svc) (fuel : Nat)
    (hfuel : svc.length < fuel) (st : CommonOperator) (hheap : st.heap.OK)
    (hempty : ∀ m, st.heap.heap_index m = -1) (hts : ∀ v, st.vertex_timestamp v ≤ st.timegen)
    (hev : st.evaluated = []) (hins : st.inserted = []) :
    ∃ st2, symmetric_init T mg tolerance handle_partial_solutions s fuel st = some st2 ∧
      InitInv mg G tolerance (st.timegen + 1) st2 [] ∧ (∀ v, st2.vertex_timestamp v ≤ st2.timegen) ∧
      st2.timegen = st.timegen + 1 ∧ st2.update_bits = st.update_bits ∧
      st2.affected_vertices = st.affected_vertices := by
  have hit : s.cache.iterate fuel s.get_svc_begin = some svc :=
    LRUCache.iterate_holds s.cache svc fuel hsvc hfuel
  obtain ⟨acc1, e1, O1, R1⟩ := outer_fold
    (symmetric_init_vertex_ok T hL tolerance handle_partial_solutions s hG) svc []
    (st, false)
    (OuterInv.at_start hheap hempty hts hev hins)
    (by rw [List.nil_append]; exact hsvc.links.nodup)
  obtain ⟨st1, depot⟩ := acc1
  obtain ⟨st2, e2, I2, t2, g2, u2, a2⟩ := init_finish hL tolerance
    (symmetric_init_depot_step_ok T hL tolerance handle_partial_solutions s 0 hG.2) depot
    O1
  have R1' : st1.timegen = st.timegen ∧ st1.update_bits = st.update_bits ∧
      st1.affected_vertices = st.affected_vertices := R1
  refine ⟨st2, ?_, I2, fun v => by rw [g2, R1'.1]; exact t2 v, by rw [g2, R1'.1],
    by rw [u2, R1'.2.1], by rw [a2, R1'.2.2]⟩
  unfold symmetric_init
  simp only [hit, e1]
  exact e2

end Phases

end CommonOperator
/-- The registry `pairActive` has the properties that the local search relies on. -/
theorem pairActive_lists : pairActive.Lists := by
  have hsz : pairActive.size = 2 := rfl
  have hget0 : pairActive.get 0 = (1, 2) := rfl
  have hget1 : pairActive.get 1 = (2, 1) := rfl
  have ht0 : MoveGenerators.get_twin_move_generator_index 0 = 1 := by decide
  have ht1 : MoveGenerators.get_twin_move_generator_index 1 = 0 := by decide
  have hcases : ∀ idx, idx < pairActive.size → idx = 0 ∨ idx = 1 := by
    intro idx h
    rw [hsz] at h
    omega
  have hlist : ∀ v idx, idx ∈ pairActive.active_move_indices_involving_1st v →
      (v = 1 ∧ idx = 0) ∨ (v = 2 ∧ idx = 1) := by
    intro v idx h
    have h2 : idx ∈ (if v = 1 then [0] else if v = 2 then [1] else []) := h
    by_cases c1 : v = 1
    · rw [if_pos c1] at h2
      exact Or.inl ⟨c1, by simpa using h2⟩
    · rw [if_neg c1] at h2
      by_cases c2 : v = 2
      · rw [if_pos c2] at h2
        exact Or.inr ⟨c2, by simpa using h2⟩
      · rw [if_neg c2] at h2
        exact absurd h2 (List.not_mem_nil _)
  refine ⟨fun idx h => ?_, fun idx h => ?_, fun idx h => ?_, fun v idx h => ?_, fun v => ?_,
    fun v idx h => ?_⟩
  · rcases hcases idx h with e | e <;> subst e
    · rw [ht0, hget0, hget1]
    · rw [ht1, hget0, hget1]
  · rcases hcases idx h with e | e <;> subst e
    · rw [ht0, hsz]; decide
    · rw [ht1, hsz]; decide
  · rcases hcases idx h with e | e <;> subst e
    · rw [hget0]; decide
    · rw [hget1]; decide
  · rcases hlist v idx h with ⟨e1, e2⟩ | ⟨e1, e2⟩ <;> subst e1 <;> subst e2
    · exact ⟨by rw [hsz]; decide, by rw [hget0]⟩
    · exact ⟨by rw [hsz]; decide, by rw [hget1]⟩
  · show (if v = 1 then [0] else if v = 2 then [1] else ([] : List Nat)).Nodup
    split_ifs <;> simp
  · rcases hlist v idx h with ⟨e1, e2⟩ | ⟨e1, e2⟩ <;> subst e1 <;> subst e2
    · rw [ht0, hget0]
      decide
    · rw [ht1, hget1]
      decide
/-! ## Solution::swap_tails -/

theorem segCost_concat (cost : Int → Int → Int) :
    ∀ (l1 : List Int) (x : Int) (l2 : List Int),
      segCost cost x (l1 ++ l2) = segCost cost x l1 + segCost cost (lastFrom x l1) l2
  | [], x, l2 => by simp [segCost, lastFrom]
  | y :: l1, x, l2 => by
    show cost x y + segCost cost y (l1 ++ l2) = cost x y + segCost cost y l1 + _
    rw [segCost_concat cost l1 y l2]
    show _ = cost x y + segCost cost y l1 + segCost cost (lastFrom y l1) l2
    ring

theorem lastFrom_concat : ∀ (l1 : List Int) (x : Int) (l2 : List Int),
    lastFrom x (l1 ++ l2) = lastFrom (lastFrom x l1) l2
  | [], _, _ => rfl
  | y :: l1, _, l2 => lastFrom_concat l1 y l2

theorem lastFrom_single (l : List Int) (x v : Int) : lastFrom x (l ++ [v]) = v := by
  rw [lastFrom_concat]
  rfl

section SwapTails

variable {I : Instance}

/-- A loop of `swap_tails` on a consistent solution: the customers `R` at the end of route
`src` are moved to the end of the cyclic list of route `dst` that starts at `w`. -/
theorem swap_tails_loop_spec (src dst : Nat) (hne : src ≠ dst) (w : Int) :
    ∀ (R Pa Tb : List Int) (s : Solution) (A : Nat → List Int) (fuel : Nat), Rep I s A →
      A src ~r (0 :: Pa ++ R) → A dst ~r (w :: Tb) → R.length < fuel →
      ∃ s2, Solution.swap_tails_loop I src dst w fuel s (R.headD 0) = some s2 ∧
        Rep I s2 (upd (upd A src (0 :: Pa)) dst (w :: Tb ++ R)) ∧
        s2.solution_cost = s.solution_cost +
          (cycCost I.cost (0 :: Pa) + cycCost I.cost (w :: Tb ++ R) -
            cycCost I.cost (0 :: Pa ++ R) - cycCost I.cost (w :: Tb)) := by
  intro R
  induction R with
  | nil =>
    intro Pa Tb s A fuel hR hs hd hf
    obtain ⟨f, rfl⟩ : ∃ f, fuel = f + 1 := ⟨fuel - 1, by simp at hf; omega⟩
    refine ⟨s, ?_, ?_, ?_⟩
    · show Solution.swap_tails_loop I src dst w (f + 1) s 0 = some s
      unfold Solution.swap_tails_loop
      simp
    · refine Rep_of_rotated hR (fun r => ?_)
      by_cases e1 : r = dst
      · rw [e1, upd_same, List.append_nil]
        exact hd
      · rw [upd_other _ _ _ _ e1]
        by_cases e2 : r = src
        · rw [e2, upd_same]
          simpa using hs
        · rw [upd_other _ _ _ _ e2]
    · simp
  | cons c R ih =>
    intro Pa Tb s A fuel hR hs hd hf
    obtain ⟨f, rfl⟩ : ∃ f, fuel = f + 1 := ⟨fuel - 1, by simp at hf; omega⟩
    have hrs := RouteRep_isRotated hs (hR.routes src)
    have hc0 : c ≠ 0 := by
      intro e
      have := hrs.nodup
      rw [e] at this
      simp at this
    have hcin : c ∈ A src := hs.mem_iff.2 (by simp)
    -- the cyclic list of `src`, read from `c`
    have rot1 : A src ~r (c :: (R ++ 0 :: Pa)) := by
      refine hs.trans ?_
      have := @List.isRotated_append _ (0 :: Pa) (c :: R)
      simpa using this
    have hnext : (s.customers_list c).next = R.headD 0 := by
      have htl : ∃ y t, R ++ 0 :: Pa = y :: t ∧ y = R.headD 0 := by
        cases R with
        | nil => exact ⟨0, Pa, rfl, rfl⟩
        | cons y R2 => exact ⟨y, R2 ++ 0 :: Pa, rfl, rfl⟩
      obtain ⟨y, t, e, ey⟩ := htl
      rw [e] at rot1
      have := ((hR.routes src).adjacent rot1).1
      unfold Solution.get_next_vertex at this
      rw [if_neg hc0] at this
      rw [this, ey]
    -- remove `c` from `src`
    obtain ⟨R1, e1⟩ := remove_vertex_ok true hR rot1 (by simp)
    -- insert `c` before `w` in `dst`
    have hd1 : upd A src (R ++ 0 :: Pa) dst ~r (w :: Tb) := by
      rw [upd_other _ _ _ _ (fun e => hne e.symm)]
      exact hd
    have hcnot : c ∉ upd A src (R ++ 0 :: Pa) dst := by
      rw [upd_other _ _ _ _ (fun e => hne e.symm)]
      exact hR.not_mem_of_ne (fun e => hne e.symm) hc0 hcin
    have hcsrc : c ∉ R ++ 0 :: Pa := by
      have := (hrs.nodup)
      have h2 : (c :: (R ++ 0 :: Pa)).Nodup := (List.IsRotated.nodup_iff
        (by have := @List.isRotated_append _ (0 :: Pa) (c :: R); simpa using this)).1 this
      exact (List.nodup_cons.1 h2).1
    have hptr : c ≠ 0 → ((Solution.remove_vertex I s true src c).1.customers_list c).route_ptr
        = 0 := fun h0 => R1.absent_ptr h0 (not_mem_routes hR h0 hcin _ (fun r2 => by
      by_cases e : r2 = src
      · right
        rw [e, upd_same]
        exact hcsrc
      · left
        rw [upd_other _ _ _ _ e]) (by rw [upd_same]; exact hcsrc))
    obtain ⟨R2, e2⟩ := insert_vertex_ok true R1 hd1 hcnot hptr (hrs.range c (by simp))
    -- the rest of the loop
    have hs2 : upd (upd A src (R ++ 0 :: Pa)) dst (c :: w :: Tb) src ~r (0 :: Pa ++ R) := by
      rw [upd_other _ _ _ _ hne, upd_same]
      have := @List.isRotated_append _ R (0 :: Pa)
      simpa using this
    have hd2 : upd (upd A src (R ++ 0 :: Pa)) dst (c :: w :: Tb) dst ~r (w :: (Tb ++ [c])) := by
      rw [upd_same]
      have := @List.isRotated_append _ [c] (w :: Tb)
      simpa using this
    obtain ⟨s3, e3, R3, c3⟩ := ih Pa (Tb ++ [c]) _ _ f R2 hs2 hd2 (by simp at hf; omega)
    refine ⟨s3, ?_, ?_, ?_⟩
    · show Solution.swap_tails_loop I src dst w (f + 1) s c = some s3
      unfold Solution.swap_tails_loop
      rw [if_pos hc0]
      dsimp only
      rw [hnext]
      exact e3
    · have hfam : upd (upd (upd (upd A src (R ++ 0 :: Pa)) dst (c :: w :: Tb)) src (0 :: Pa)) dst
          (w :: (Tb ++ [c]) ++ R) = upd (upd A src (0 :: Pa)) dst (w :: Tb ++ c :: R) := by
        funext r
        by_cases e1 : r = dst
        · rw [e1, upd_same, upd_same]
          simp
        · rw [upd_other _ _ _ _ e1, upd_other _ _ _ _ e1]
          by_cases e2 : r = src
          · rw [e2, upd_same, upd_same]
          · rw [upd_other _ _ _ _ e2, upd_other _ _ _ _ e2, upd_other _ _ _ _ e1,
              upd_other _ _ _ _ e2]
      rw [← hfam]
      exact R3
    · have q1 : cycCost I.cost (R ++ 0 :: Pa) = cycCost I.cost (0 :: Pa ++ R) :=
        (cycCost_isRotated
          (by have := @List.isRotated_append _ R (0 :: Pa); simpa using this)).symm
      have q2 : cycCost I.cost (c :: (R ++ 0 :: Pa)) = cycCost I.cost (0 :: Pa ++ c :: R) :=
        (cycCost_isRotated
          (by have := @List.isRotated_append _ (c :: R) (0 :: Pa); simpa using this)).symm
      have q3 : cycCost I.cost (c :: w :: Tb) = cycCost I.cost (w :: (Tb ++ [c])) :=
        (cycCost_isRotated
          (by have := @List.isRotated_append _ [c] (w :: Tb); simpa using this)).symm
      have q4 : w :: (Tb ++ [c]) ++ R = w :: Tb ++ c :: R := by simp
      rw [c3, e2, e1, q1, q2, q3, q4]
      ring

end SwapTails
section SwapTails2

variable {I : Instance} {s : Solution} {A : Nat → List Int}

/-- Setting the flag `needs_cumulative_load_update` of a route keeps the representation. -/
theorem Rep_flag (hR : Rep I s A) (r : Nat) (b : Bool) :
    Rep I (s.set_route_needs_cumulative_load_update r b) A := by
  refine Rep_of_agree hR (fun u => ⟨rfl, rfl, rfl, rfl⟩) (fun q => ?_) rfl rfl
  by_cases e : q = r
  · subst e
    simp [RouteNode.agree]
  · simp [RouteNode.agree, e]

theorem cycCost_split (cost : Int → Int → Int) (P W : List Int) (i : Int) :
    cycCost cost (0 :: P ++ i :: W) = segCost cost 0 (P ++ [i]) + segCost cost i (W ++ [0]) := by
  have e : (0 :: P ++ i :: W) = 0 :: ((P ++ [i]) ++ W) := by simp
  rw [e, cycCost_cons]
  have e2 : (P ++ [i] ++ W) ++ [0] = (P ++ [i]) ++ (W ++ [0]) := by simp
  rw [e2, segCost_concat, lastFrom_single]

theorem cycCost_split2 (cost : Int → Int → Int) (Q W : List Int) :
    cycCost cost (0 :: Q ++ W) = segCost cost 0 Q + segCost cost (lastFrom 0 Q) (W ++ [0]) := by
  have e : (0 :: Q ++ W) = 0 :: (Q ++ W) := by simp
  rw [e, cycCost_cons]
  have e2 : (Q ++ W) ++ [0] = Q ++ (W ++ [0]) := by simp
  rw [e2, segCost_concat]

theorem segCost_first (cost : Int → Int → Int) (X : List Int) :
    ∃ t, ∀ x, segCost cost x (X ++ [0]) = cost x (X.headD 0) + t := by
  cases X with
  | nil => exact ⟨0, fun x => by simp [segCost]⟩
  | cons y X2 => exact ⟨segCost cost y (X2 ++ [0]), fun x => by simp [segCost]⟩

/-- Method `swap_tails` on a consistent solution: route `iRoute` becomes its part up to `i`
followed by the part of `jRoute` from `j` on, route `jRoute` becomes its part before `j`
followed by the part of `iRoute` after `i`, and the cost changes as stated. -/
theorem swap_tails_ok (hR : Rep I s A) {iRoute jRoute : Nat} (hne : iRoute ≠ jRoute)
    {i j : Int} {P X Q Y : List Int} (hAi : A iRoute ~r (0 :: P ++ i :: X))
    (hAj : A jRoute ~r (0 :: Q ++ j :: Y)) (fuel : Nat) (hf1 : Y.length + 1 < fuel)
    (hf2 : X.length < fuel) :
    ∃ s2, Solution.swap_tails I s i iRoute j jRoute fuel = some s2 ∧
      Rep I s2 (upd (upd A iRoute (0 :: P ++ i :: j :: Y)) jRoute (0 :: Q ++ X)) ∧
      s2.get_cost = s.get_cost +
        (I.cost i j + I.cost (s.get_prev_vertex jRoute j) (s.get_next_vertex iRoute i) -
          I.cost i (s.get_next_vertex iRoute i) - I.cost (s.get_prev_vertex jRoute j) j) := by
  have hri := RouteRep_isRotated hAi (hR.routes iRoute)
  have hrj := RouteRep_isRotated hAj (hR.routes jRoute)
  have hi0 : i ≠ 0 := by
    intro e
    have := hri.nodup
    rw [e] at this
    simp at this
  -- the successor of `i` and the predecessor of `j`
  have roti : A iRoute ~r (i :: (X ++ 0 :: P)) := by
    refine hAi.trans ?_
    have := @List.isRotated_append _ (0 :: P) (i :: X)
    simpa using this
  have rotj : A jRoute ~r (j :: (Y ++ 0 :: Q)) := by
    refine hAj.trans ?_
    have := @List.isRotated_append _ (0 :: Q) (j :: Y)
    simpa using this
  have hnext : s.get_next_vertex iRoute i = X.headD 0 := by
    have htl : ∃ y t, X ++ 0 :: P = y :: t ∧ y = X.headD 0 := by
      cases X with
      | nil => exact ⟨0, P, rfl, rfl⟩
      | cons y X2 => exact ⟨y, X2 ++ 0 :: P, rfl, rfl⟩
    obtain ⟨y, t, e, ey⟩ := htl
    rw [e] at roti
    rw [((hR.routes iRoute).adjacent roti).1, ey]
  have hprev : s.get_prev_vertex jRoute j = lastFrom 0 Q := by
    have htl : ∃ y t, Y ++ 0 :: Q = y :: t ∧ lastFrom y t = lastFrom 0 Q := by
      cases Y with
      | nil => exact ⟨0, Q, rfl, rfl⟩
      | cons y Y2 =>
        refine ⟨y, Y2 ++ 0 :: Q, rfl, ?_⟩
        rw [lastFrom_concat]
        rfl
    obtain ⟨y, t, e, ey⟩ := htl
    rw [e] at rotj
    rw [((hR.routes jRoute).adjacent rotj).2.2.2.1, ey]
  have hinext : (s.customers_list i).next = X.headD 0 := by
    rw [← hnext]
    unfold Solution.get_next_vertex
    rw [if_neg hi0]
  -- the cyclic list of `iRoute`, read from the successor of `i`
  have hTb : ∃ Tb, X ++ 0 :: (P ++ [i]) = X.headD 0 :: Tb := by
    cases X with
    | nil => exact ⟨P ++ [i], rfl⟩
    | cons y X2 => exact ⟨X2 ++ 0 :: (P ++ [i]), rfl⟩
  obtain ⟨Tb, eTb⟩ := hTb
  have hd1 : A iRoute ~r (X.headD 0 :: Tb) := by
    rw [← eTb]
    refine hAi.trans ?_
    have := @List.isRotated_append _ (0 :: (P ++ [i])) X
    simpa using this
  -- first loop
  obtain ⟨s1, e1, R1, c1⟩ := swap_tails_loop_spec (I := I) jRoute iRoute (fun e => hne e.symm)
    (X.headD 0) (j :: Y) Q Tb s A fuel hR hAj hd1 (by simpa using hf1)
  -- second loop
  have hs2 : upd (upd A jRoute (0 :: Q)) iRoute (X.headD 0 :: Tb ++ j :: Y) iRoute ~r
      (0 :: (P ++ i :: j :: Y) ++ X) := by
    rw [upd_same]
    have e : X.headD 0 :: Tb ++ j :: Y = X ++ (0 :: (P ++ i :: j :: Y)) := by
      rw [show X.headD 0 :: Tb ++ j :: Y = (X.headD 0 :: Tb) ++ j :: Y by rfl, ← eTb]
      simp
    rw [e]
    exact List.isRotated_append
  have hd2 : upd (upd A jRoute (0 :: Q)) iRoute (X.headD 0 :: Tb ++ j :: Y) jRoute ~r
      (0 :: Q) := by
    rw [upd_other _ _ _ _ (fun e => hne e.symm), upd_same]
  obtain ⟨s2, e2, R2, c2⟩ := swap_tails_loop_spec (I := I) iRoute jRoute hne 0 X
    (P ++ i :: j :: Y) Q s1 _ fuel R1 hs2 hd2 hf2
  have hfam : upd (upd (upd (upd A jRoute (0 :: Q)) iRoute (X.headD 0 :: Tb ++ j :: Y)) iRoute
      (0 :: (P ++ i :: j :: Y))) jRoute (0 :: Q ++ X) =
      upd (upd A iRoute (0 :: P ++ i :: j :: Y)) jRoute (0 :: Q ++ X) := by
    funext r
    by_cases a1 : r = jRoute
    · rw [a1, upd_same, upd_same]
    · rw [upd_other _ _ _ _ a1, upd_other _ _ _ _ a1]
      by_cases a2 : r = iRoute
      · rw [a2, upd_same, upd_same]
        simp
      · rw [upd_other _ _ _ _ a2, upd_other _ _ _ _ a2, upd_other _ _ _ _ a2,
          upd_other _ _ _ _ a1]
  rw [hfam] at R2
  refine ⟨_, ?_, Rep_flag (Rep_flag R2 iRoute true) jRoute true, ?_⟩
  · unfold Solution.swap_tails
    dsimp only
    rw [hinext]
    have e1b : Solution.swap_tails_loop I jRoute iRoute (X.headD 0) fuel s j = some s1 := e1
    rw [e1b]
    dsimp only
    rw [e2]
  · show s2.solution_cost = s.solution_cost + _
    have q1 : cycCost I.cost (X.headD 0 :: Tb) = cycCost I.cost (0 :: P ++ i :: X) :=
      cycCost_isRotated (hAi.symm.trans hd1)
    have q2 : cycCost I.cost (X.headD 0 :: Tb ++ j :: Y) =
        cycCost I.cost (0 :: (P ++ i :: j :: Y) ++ X) := by
      have := hs2
      rw [upd_same] at this
      exact (cycCost_isRotated this).symm
    obtain ⟨t, ht⟩ := segCost_first I.cost X
    have k5 : ∀ x, segCost I.cost x ((j :: Y) ++ [0]) =
        I.cost x j + segCost I.cost j (Y ++ [0]) := fun x => by simp [segCost]
    have E1 : cycCost I.cost (0 :: (P ++ i :: j :: Y)) =
        segCost I.cost 0 (P ++ [i]) + (I.cost i j + segCost I.cost j (Y ++ [0])) := by
      rw [show (0 :: (P ++ i :: j :: Y)) = (0 :: P ++ i :: (j :: Y)) from rfl,
        cycCost_split, k5]
    have E2 : cycCost I.cost (0 :: P ++ i :: X) =
        segCost I.cost 0 (P ++ [i]) + (I.cost i (X.headD 0) + t) := by
      rw [cycCost_split, ht]
    have E3 : cycCost I.cost (0 :: Q ++ X) =
        segCost I.cost 0 Q + (I.cost (lastFrom 0 Q) (X.headD 0) + t) := by
      rw [cycCost_split2, ht]
    have E4 : cycCost I.cost (0 :: Q ++ j :: Y) =
        segCost I.cost 0 Q + (I.cost (lastFrom 0 Q) j + segCost I.cost j (Y ++ [0])) := by
      rw [cycCost_split2, k5]
    rw [c2, c1, q1, q2, hnext, hprev, E1, E2, E3, E4]
    ring

end SwapTails2
/-! ## The claims on the cache, on `append_route` and on the loads -/

/-- C15: for every capacity `H ≥ 1` and every sequence of `insert` and `clear` calls (no
`insert` of `dummy_vertex`) on the cache built by the constructor, the calls return (the loop
of `clear` ends within `H + 1` passes) and the cache refines the duplicate-free list
`lruList H [] calls` of the specification: `insert(v)` of an absent `v` puts `v` at the front
and drops the last entry if the list already held `H` entries, `insert(v)` of a present `v`
moves it to the front, `clear()` empties the list. Iterating `begin()`, `get_next(..)` until
`end()` yields exactly that list, `size()` is its length, which never exceeds `H`. -/
theorem lru_cache_refines_list (H : Nat) (hH : 1 ≤ H) (calls : List LruCall)
    (hv : ∀ a ∈ calls, a ≠ LruCall.insert (-1)) (fuel : Nat) (hf : H < fuel) :
    ∃ c, LRUCache.calls fuel (LRUCache.create H) calls = some c ∧
      c.iterate fuel c.head = some (lruList H [] calls) ∧
      c.size = (lruList H [] calls).length ∧
      (lruList H [] calls).length ≤ H ∧ (lruList H [] calls).Nodup := by
  obtain ⟨c, h1, h2, h3⟩ := LRUCache.calls_hold H hH fuel hf calls (LRUCache.create H) []
    (LRUCache.create_holds H) rfl hv
  have hlen : (lruList H [] calls).length ≤ H := by
    have := h2.length_le
    rw [h3] at this
    exact_mod_cast this
  exact ⟨c, h1, LRUCache.iterate_holds c _ fuel h2 (by omega), h2.counter_eq, hlen,
    h2.links.nodup⟩

theorem lru_cache_refines_list_witness :
    ∃ c, LRUCache.calls 3 (LRUCache.create (2 : Nat))
        [LruCall.insert 1, LruCall.insert 2, LruCall.insert 1, LruCall.insert 3,
          LruCall.clear, LruCall.insert 4, LruCall.insert 5, LruCall.insert 6] = some c ∧
      c.iterate 3 c.head = some (lruList 2 []
        [LruCall.insert 1, LruCall.insert 2, LruCall.insert 1, LruCall.insert 3,
          LruCall.clear, LruCall.insert 4, LruCall.insert 5, LruCall.insert 6]) ∧
      c.size = (lruList 2 []
        [LruCall.insert 1, LruCall.insert 2, LruCall.insert 1, LruCall.insert 3,
          LruCall.clear, LruCall.insert 4, LruCall.insert 5, LruCall.insert 6]).length ∧
      (lruList 2 []
        [LruCall.insert 1, LruCall.insert 2, LruCall.insert 1, LruCall.insert 3,
          LruCall.clear, LruCall.insert 4, LruCall.insert 5, LruCall.insert 6]).length ≤ 2 ∧
      (lruList 2 []
        [LruCall.insert 1, LruCall.insert 2, LruCall.insert 1, LruCall.insert 3,
          LruCall.clear, LruCall.insert 4, LruCall.insert 5, LruCall.insert 6]).Nodup :=
  lru_cache_refines_list 2 (by decide)
    [LruCall.insert 1, LruCall.insert 2, LruCall.insert 1, LruCall.insert 3,
      LruCall.clear, LruCall.insert 4, LruCall.insert 5, LruCall.insert 6] (by decide) 3
    (by decide)

/-- C11, counterexample: `lineOne` has the single route `1: depot, 1, depot` and a cache of
capacity 5 that holds customer 1 only. After `insert_vertex_before(1, depot, 2)` the
iteration from `get_svc_begin` meets the depot (`where`) and customer 1 (the new predecessor
of customer 2) and then ends: the inserted customer 2 is not met. -/
theorem insert_vertex_before_svc_vertex :
    3 ≤ lineOne.cache.cache_size ∧
    lineOne.cache.iterate 6 lineOne.get_svc_begin = some [1] ∧
    (Solution.insert_vertex_before lineInstance lineOne true 1 0 2).get_prev_vertex 1 2 = 1 ∧
    (Solution.insert_vertex_before lineInstance lineOne true 1 0 2).cache.iterate 6
      (Solution.insert_vertex_before lineInstance lineOne true 1 0 2).get_svc_begin
        = some [0, 1] ∧
    (Solution.insert_vertex_before lineInstance lineOne true 1 0 2).cache.reaches 6
      (Solution.insert_vertex_before lineInstance lineOne true 1 0 2).get_svc_begin 2
        = false := by
  decide

/-- C11: let the cache of the solution hold the list `l` (any list) and have capacity
`H ≥ 2`. After `insert_vertex_before(route, where, v)`, of a customer `v` or of the depot
(then `where` and its predecessor are customers), the cache holds the list obtained from `l`
by `insert(prev)` and `insert(where)`, where `prev` is the predecessor of `where` before the
call, that is the new predecessor of `v`. Hence `where` and `prev` are met when iterating
from `get_svc_begin`. The call does not insert `v`: if `v` was not in the cache before the
call it is not in the cache after it. -/
theorem insert_vertex_before_svc (I : Instance) (s : Solution) (ra : Bool) (route : Nat)
    (wh v : Int) (H : Nat) (l : List Int) (hl : s.cache.Holds l)
    (hH : s.cache.cache_size = H) (hH2 : 2 ≤ H) (hpre : s.InsertPre route wh v)
    (hw : wh ≠ -1) (hp : s.get_prev_vertex route wh ≠ -1) (fuel : Nat) (hf : H ≤ fuel) :
    (Solution.insert_vertex_before I s ra route wh v).cache.Holds
      (lruInsert H wh (lruInsert H (s.get_prev_vertex route wh) l)) ∧
    (Solution.insert_vertex_before I s ra route wh v).get_prev_vertex route v =
      s.get_prev_vertex route wh ∧
    (Solution.insert_vertex_before I s ra route wh v).cache.reaches fuel
      (Solution.insert_vertex_before I s ra route wh v).get_svc_begin wh = true ∧
    (Solution.insert_vertex_before I s ra route wh v).cache.reaches fuel
      (Solution.insert_vertex_before I s ra route wh v).get_svc_begin
      (s.get_prev_vertex route wh) = true ∧
    (v ∉ l → (Solution.insert_vertex_before I s ra route wh v).cache.reaches fuel
      (Solution.insert_vertex_before I s ra route wh v).get_svc_begin v = false) := by
  obtain ⟨hwv, hpv, hd⟩ := hpre
  have hc : (Solution.insert_vertex_before I s ra route wh v).cache =
      (s.cache.insert (s.get_prev_vertex route wh)).insert wh := by
    rw [Solution.insert_vertex_cache]
    by_cases hv : v = 0
    · rw [if_pos hv]
      unfold Solution.get_prev_vertex
      rw [if_neg (hd hv).1]
    · rw [if_neg hv]
  obtain ⟨h1, h1s⟩ := LRUCache.insert_holds s.cache H l (s.get_prev_vertex route wh) hl hH
    (by omega) hp
  obtain ⟨h2, h2s⟩ := LRUCache.insert_holds _ H _ wh h1 h1s (by omega) hw
  rw [← hc] at h2 h2s
  have hlen : (lruInsert H wh (lruInsert H (s.get_prev_vertex route wh) l)).length ≤ fuel := by
    have := h2.length_le
    rw [h2s] at this
    have : (lruInsert H wh (lruInsert H (s.get_prev_vertex route wh) l)).length ≤ H := by
      exact_mod_cast this
    omega
  obtain ⟨m1, m2⟩ := mem_lruInsert_twice H hH2 (s.get_prev_vertex route wh) wh l
  have hb : (Solution.insert_vertex_before I s ra route wh v).get_svc_begin =
      (lruInsert H wh (lruInsert H (s.get_prev_vertex route wh) l)).headD (-1) :=
    h2.links.head_eq
  refine ⟨h2, ?_, ?_, ?_, ?_⟩
  · have := Solution.insert_vertex_prev I s ra route wh v ⟨hwv, hpv, hd⟩ v
    rw [this, if_neg (Ne.symm hwv), if_pos rfl]
  · rw [hb]
    exact LRUCache.reaches_of_mem _ wh _ fuel (-1) h2.links.valid h2.links.chain hlen m2
  · rw [hb]
    exact LRUCache.reaches_of_mem _ _ _ fuel (-1) h2.links.valid h2.links.chain hlen m1
  · intro hvl
    rw [hb]
    by_contra hr
    have hr2 := LRUCache.reaches_imp_mem _ v _ fuel (-1) h2.links.chain
      (by simpa using hr)
    exact not_mem_lruInsert H v wh _
      (not_mem_lruInsert H v _ l hvl (Ne.symm hpv)) (Ne.symm hwv) hr2

theorem insert_vertex_before_svc_witness :
    (Solution.insert_vertex_before lineInstance lineOne true 1 0 2).cache.Holds
      (lruInsert 5 0 (lruInsert 5 (lineOne.get_prev_vertex 1 0) [1])) ∧
    (Solution.insert_vertex_before lineInstance lineOne true 1 0 2).get_prev_vertex 1 2 =
      lineOne.get_prev_vertex 1 0 ∧
    (Solution.insert_vertex_before lineInstance lineOne true 1 0 2).cache.reaches 5
      (Solution.insert_vertex_before lineInstance lineOne true 1 0 2).get_svc_begin 0 = true ∧
    (Solution.insert_vertex_before lineInstance lineOne true 1 0 2).cache.reaches 5
      (Solution.insert_vertex_before lineInstance lineOne true 1 0 2).get_svc_begin
      (lineOne.get_prev_vertex 1 0) = true ∧
    ((2 : Int) ∉ [1] →
      (Solution.insert_vertex_before lineInstance lineOne true 1 0 2).cache.reaches 5
        (Solution.insert_vertex_before lineInstance lineOne true 1 0 2).get_svc_begin 2
        = false) :=
  insert_vertex_before_svc lineInstance lineOne true 1 0 2 5 [1] lineOne_cache.1
    lineOne_cache.2 (by decide) ⟨by decide, by decide, by decide⟩ (by decide) (by decide)
    5 (by decide)

/-- C12: let `R ≠ S` be two routes of a represented solution that have their depot and serve
the customers `LR` and `LS`, both non-empty, and let `L` be the linked list of routes, with
`S` in it. Then `append_route(R, S)` returns, and afterwards the customers of `R` are `LR`
followed by `LS`, the load and the size of `R` are the sums of those of `R` and `S`, every
customer of `LS` has the route index `R`, route `S` is not in the solution and is not in the
linked list of routes any more (the other routes keep their order), the solution is again
represented, and the total cost has changed by
`cost(last(R), first(S)) - cost(last(R), depot) - cost(depot, first(S))`. -/
theorem append_route_spec (I : Instance) (s : Solution) (A : Nat → List Int) (R S : Nat)
    (hR : Rep I s A) (hRS : R ≠ S) (h0R : (0 : Int) ∈ A R) (h0S : (0 : Int) ∈ A S)
    (hcR : ∃ u ∈ A R, u ≠ 0) (hcS : ∃ u ∈ A S, u ≠ 0) (L : List Nat) (hL : s.RouteList L)
    (hSL : S ∈ L) (fuel : Nat) (hf : I.vertices_num < fuel) (hfL : L.length < fuel) :
    ∃ s9 LR LS, Solution.append_route I s R S fuel = some s9 ∧
      s.route_customers R fuel = some LR ∧ s.route_customers S fuel = some LS ∧
      LR ≠ [] ∧ LS ≠ [] ∧
      s9.route_customers R fuel = some (LR ++ LS) ∧
      s9.get_route_load R = s.get_route_load R + s.get_route_load S ∧
      s9.get_route_size R = s.get_route_size R + s.get_route_size S ∧
      (∀ c ∈ LS, (s9.customers_list c).route_ptr = R) ∧
      s9.is_route_in_solution S = false ∧
      s9.routes_from fuel s9.get_first_route = some (L.erase S) ∧
      S ∉ L.erase S ∧
      Rep I s9 (upd (upd A S []) R (0 :: (LR ++ LS))) ∧
      s9.solution_cost = s.solution_cost +
        (I.cost (s.get_last_customer R) (s.get_first_customer S)
          - I.cost (s.get_last_customer R) 0 - I.cost 0 (s.get_first_customer S)) := by
  obtain ⟨LR, hLR, hne1⟩ := exists_rotated_of_mem_ne h0R hcR
  obtain ⟨LS, hLS, hne2⟩ := exists_rotated_of_mem_ne h0S hcS
  have hR1 := Rep_isRotated hR hLR
  have hLS2 : upd A R (0 :: LR) S ~r (0 :: LS) := by
    rw [upd_other _ _ _ _ (fun h => hRS h.symm)]; exact hLS
  have hR2 := Rep_isRotated hR1 hLS2
  have hAR : upd (upd A R (0 :: LR)) S (0 :: LS) R = 0 :: LR := by
    rw [upd_other _ _ _ _ hRS, upd_same]
  have hAS : upd (upd A R (0 :: LR)) S (0 :: LS) S = 0 :: LS := upd_same _ S _
  have hlen : LS.length < fuel := by
    have h1 := hR.length_le S
    have h2 := hLS.perm.length_eq
    simp only [List.length_cons] at h2
    omega
  obtain ⟨s9, e9, hcust, hroute, _, hS, hcost, _⟩ :=
    append_route_fields hR2 hRS hAR hAS hne2 hlen
  obtain ⟨s9c, e9c, hrepc, _⟩ := append_route_rep hR2 hRS hAR hAS hne1 hne2 hlen
  have e1 : s9c = s9 := Option.some.inj (e9c.symm.trans e9)
  subst e1
  have rR := hR2.routes R
  have rS := hR2.routes S
  rw [hAR] at rR
  rw [hAS] at rS
  have rR9 := hrepc.routes R
  rw [upd_same] at rR9
  obtain ⟨a, b, hab⟩ := List.append_of_mem hSL
  have hlist := Solution.append_route_list I s s9c R S fuel a b (hab ▸ hL) e9
  have hnd := hL.nodup
  have herase : L.erase S = a ++ b := by
    rw [hab] at hnd ⊢
    have hn := List.nodup_append.1 hnd
    have hSa : S ∉ a := fun e => hn.2.2 e (List.mem_cons_self _ _)
    rw [List.erase_append_right _ hSa, List.erase_cons_head]
  have hlast := last_of_routeRep rR
  have hfirst : (s.routes_list S).first_customer = LS.head! := by
    cases LS with
    | nil => exact absurd rfl hne2
    | cons x t2 => exact ((chain_of_routeRep rS).2.2 x t2 rfl).1
  refine ⟨s9c, LR, LS, e9, route_customers_of_routeRep rR hf, route_customers_of_routeRep rS hf,
    hne1, hne2, route_customers_of_routeRep rR9 hf, hroute.2.2.1, hroute.2.2.2.1, ?_, hS, ?_,
    ?_, ?_, ?_⟩
  · intro c hc
    rw [(hcust c).2.2.2, if_pos hc]
  · rw [herase]
    exact Solution.routes_from_list s9c (a ++ b) fuel hlist (by
      have : (a ++ b).length ≤ L.length := by rw [hab]; simp
      omega)
  · exact fun h => (List.Nodup.mem_erase_iff hnd).1 h |>.1 rfl
  · have hA2 : upd (upd (upd (upd A R (0 :: LR)) S (0 :: LS)) S []) R (0 :: (LR ++ LS)) =
        upd (upd A S []) R (0 :: (LR ++ LS)) := by
      funext q
      by_cases hq : q = R
      · subst hq; simp [upd_same]
      · by_cases hq2 : q = S
        · subst hq2
          rw [upd_other _ _ _ _ hq, upd_same, upd_other _ _ _ _ hq, upd_same]
        · rw [upd_other _ _ _ _ hq, upd_other _ _ _ _ hq2, upd_other _ _ _ _ hq2,
            upd_other _ _ _ _ hq, upd_other _ _ _ _ hq, upd_other _ _ _ _ hq2]
    rw [← hA2]
    exact hrepc
  · rw [hcost]
    unfold Solution.get_last_customer Solution.get_first_customer
    rw [hlast, hfirst]

theorem append_route_spec_witness :
    ∃ s9 LR LS, Solution.append_route lineInstance lineBoth 1 2 5 = some s9 ∧
      lineBoth.route_customers 1 5 = some LR ∧ lineBoth.route_customers 2 5 = some LS ∧
      LR ≠ [] ∧ LS ≠ [] ∧
      s9.route_customers 1 5 = some (LR ++ LS) ∧
      s9.get_route_load 1 = lineBoth.get_route_load 1 + lineBoth.get_route_load 2 ∧
      s9.get_route_size 1 = lineBoth.get_route_size 1 + lineBoth.get_route_size 2 ∧
      (∀ c ∈ LS, (s9.customers_list c).route_ptr = 1) ∧
      s9.is_route_in_solution 2 = false ∧
      s9.routes_from 5 s9.get_first_route = some ([2, 1].erase 2) ∧
      2 ∉ [2, 1].erase 2 ∧
      Rep lineInstance s9 (upd (upd lineBothA 2 []) 1 (0 :: (LR ++ LS))) ∧
      s9.solution_cost = lineBoth.solution_cost +
        (lineInstance.cost (lineBoth.get_last_customer 1) (lineBoth.get_first_customer 2)
          - lineInstance.cost (lineBoth.get_last_customer 1) 0
          - lineInstance.cost 0 (lineBoth.get_first_customer 2)) :=
  append_route_spec lineInstance lineBoth lineBothA 1 2 lineBoth_rep.1 (by decide) (by decide)
    (by decide) ⟨1, by decide, by decide⟩ ⟨2, by decide, by decide⟩ [2, 1] lineBoth_routeList
    (by decide) 5 (by decide) (by decide)

/-- C14, counterexample: in `zeroInstance` the demands are non-negative (all of them are 0).
In the solution `zeroOne` route 1 is present, the walk over it meets customer 1, its stored
load 0 is the sum of the demands of its customers and its stored size is 1; yet
`is_route_empty(1)` returns true. -/
theorem is_route_empty_zero_demand :
    (∀ c ∈ [(1 : Int), 2, 3], 0 ≤ zeroInstance.demand c) ∧
    zeroOne.is_route_in_solution 1 = true ∧
    zeroOne.route_customers 1 5 = some [1] ∧
    zeroOne.get_route_load 1 = ([(1 : Int)].map zeroInstance.demand).sum ∧
    zeroOne.get_route_size 1 = (([(1 : Int)].length : Nat) : Int) ∧
    zeroOne.is_route_empty 1 = true := by
  decide

/-- C14: let route `r` be present, let the walk over it meet the customers `t`, and let its
stored load be the sum of the demands of `t` (its stored size being the length of `t`). If
the demands of these customers are positive, `is_route_empty(r)` returns true exactly when
the route serves no customer; it is then also the case that the stored size is 0. -/
theorem is_route_empty_iff (I : Instance) (s : Solution) (r : Nat) (t : List Int) (fuel : Nat)
    (hp : s.is_route_in_solution r = true) (hwalk : s.route_customers r fuel = some t)
    (hload : s.get_route_load r = (t.map I.demand).sum)
    (hsize : s.get_route_size r = (t.length : Int))
    (hpos : ∀ c ∈ t, 0 < I.demand c) :
    (s.is_route_empty r = true ↔ t = []) ∧ (s.is_route_empty r = true ↔ s.get_route_size r = 0) := by
  have key : ∀ l : List Int, (∀ c ∈ l, 0 < I.demand c) → ((l.map I.demand).sum = 0 ↔ l = []) := by
    intro l
    induction l with
    | nil => intro _; simp
    | cons x l ih =>
      intro h
      have h1 := h x (List.mem_cons_self _ _)
      have h2 : 0 ≤ (l.map I.demand).sum := by
        refine List.sum_nonneg (fun y hy => ?_)
        obtain ⟨c, hc, rfl⟩ := List.mem_map.1 hy
        exact le_of_lt (h c (List.mem_cons_of_mem _ hc))
      simp only [List.map_cons, List.sum_cons]
      constructor
      · intro e; omega
      · intro e; cases e
  have h1 : s.is_route_empty r = true ↔ t = [] := by
    unfold Solution.is_route_empty
    unfold Solution.get_route_load at hload
    rw [decide_eq_true_iff, hload]
    exact key t hpos
  refine ⟨h1, h1.trans ?_⟩
  rw [hsize]
  constructor
  · intro e; rw [e]; rfl
  · intro e
    have : t.length = 0 := by exact_mod_cast e
    exact List.length_eq_zero.1 this

theorem is_route_empty_iff_witness :
    (lineOne.is_route_empty 1 = true ↔ [(1 : Int)] = []) ∧
    (lineOne.is_route_empty 1 = true ↔ lineOne.get_route_size 1 = 0) :=
  is_route_empty_iff lineInstance lineOne 1 [1] 5 (by decide) (by decide) (by decide)
    (by decide) (by decide)

/-- C13: let the solution `s`, described by the cycles `A`, be reached from the freshly reset
solution by any sequence of mutations (`build_one_customer_route`, `remove_vertex`,
`insert_vertex_before`, `remove_route`, `reverse_route_path`, `append_route`, the flag
assignments of `swap_tails` and `split`, and the two getters themselves), for a symmetric cost
function. Let `c` be a customer of a route `r` that has its depot, the walk from the first
customer of `r` meeting `p`, then `c`, then `q`. Then `get_route_load_before_included(c)`
returns the sum of the demands of `p` and `c`, `get_route_load_after_included(c)` returns the
sum of the demands of `c` and `q`, and if the flag `needs_cumulative_load_update` of `r` is
false the stored `load_before` and `load_after` of `c` already are these sums. -/
theorem cumulative_loads_spec (I : Instance) (hsym : CostSym I) (fuel : Nat)
    (hf : I.vertices_num < fuel) (s : Solution) (A : Nat → List Int)
    (h : Mutated I fuel s A) (r : Nat) (p q : List Int) (c : Int)
    (hA : A r ~r (0 :: (p ++ c :: q))) :
    s.route_customers r fuel = some (p ++ c :: q) ∧
    (∃ s2, Solution.get_route_load_before_included I s c fuel =
      some (((p ++ [c]).map I.demand).sum, s2)) ∧
    (∃ s2, Solution.get_route_load_after_included I s c fuel =
      some (((c :: q).map I.demand).sum, s2)) ∧
    ((s.routes_list r).needs_cumulative_load_update = false →
      (s.customers_list c).load_before = ((p ++ [c]).map I.demand).sum ∧
      (s.customers_list c).load_after = ((c :: q).map I.demand).sum) := by
  obtain ⟨hR, hC⟩ := Mutated.inv hsym hf h
  have rr := RouteRep_isRotated hA (hR.routes r)
  have key : ∀ cl : Int → CustomerNode,
      CumFresh I cl 0 (((p ++ c :: q).map I.demand).sum) (p ++ c :: q) →
      (cl c).load_before = ((p ++ [c]).map I.demand).sum ∧
      (cl c).load_after = ((c :: q).map I.demand).sum := by
    intro cl hcl
    obtain ⟨e1, e2⟩ := CumFresh_mid p 0 _ hcl
    rw [e1, e2]
    simp only [List.map_append, List.sum_append, List.map_cons, List.sum_cons]
    constructor <;> ring
  obtain ⟨s2, e2, _, _, h4, _⟩ := Solution.refresh_spec hR hC hA
    (List.mem_append_right p (List.mem_cons_self c q)) hf
  refine ⟨route_customers_of_routeRep rr hf, ⟨s2, ?_⟩, ⟨s2, ?_⟩, fun hflag => key _ (hC r _ hA hflag)⟩
  · unfold Solution.get_route_load_before_included
    rw [e2, Option.map_some', (key _ h4).1]
  · unfold Solution.get_route_load_after_included
    rw [e2, Option.map_some', (key _ h4).2]

theorem cumulative_loads_spec_witness :
    lineTwo.route_customers 1 5 = some ([1] ++ 2 :: []) ∧
    (∃ s2, Solution.get_route_load_before_included lineInstance lineTwo 2 5 =
      some ((([1] ++ [2]).map lineInstance.demand).sum, s2)) ∧
    (∃ s2, Solution.get_route_load_after_included lineInstance lineTwo 2 5 =
      some (((2 :: []).map lineInstance.demand).sum, s2)) ∧
    ((lineTwo.routes_list 1).needs_cumulative_load_update = false →
      (lineTwo.customers_list 2).load_before = (([1] ++ [2]).map lineInstance.demand).sum ∧
      (lineTwo.customers_list 2).load_after = ((2 :: []).map lineInstance.demand).sum) :=
  cumulative_loads_spec lineInstance lineInstance_sym 5 (by decide) lineTwo lineTwoA
    lineTwo_mutated 1 [1] [] 2 (by decide)

theorem HeapReach.of_calls {delta : Nat → Int} : ∀ (calls : List HeapCall) (st st2 : MGHeap),
    HeapReach delta st → st.calls calls = some st2 → HeapReach delta st2
  | [], st, st2, h, e => by
    simp only [MGHeap.calls, Option.some.injEq] at e
    rw [← e]; exact h
  | c :: rest, st, st2, h, e => by
    simp only [MGHeap.calls] at e
    by_cases hv : c.valid st
    · rw [if_pos hv] at e
      cases hc : st.call c with
      | none => rw [hc] at e; cases e
      | some st1 =>
        rw [hc] at e
        exact HeapReach.of_calls rest st1 st2 (HeapReach.step c h hv hc) e
    · rw [if_neg hv] at e
      cases e

theorem heapDemo_reach : HeapReach heapDelta heapDemo :=
  HeapReach.of_calls heapCalls (MGHeap.empty heapDelta) heapDemo HeapReach.init
    (some_getD_of_isSome (by decide))

/-- C16: in every state reached from the empty heap by `reset`, `insert` (of a generator
that is not in the heap), `get` (on a heap that is not empty), `remove(heap index)` and
`change_value(heap index, value)` (the heap index being a position of the heap), the check
`is_heap` of the source holds: the generator stored at position `n` carries heap index `n` and
no child has a smaller delta than its parent; the generators in the heap are distinct and
every generator that is not in the heap carries heap index -1. Every valid call returns,
the generator taken out by `remove` or `get` carries heap index -1 afterwards, and after
`reset` every generator does. -/
theorem heap_invariants (delta : Nat → Int) (st : MGHeap) (h : HeapReach delta st) :
    st.is_heap ∧ st.OK ∧
    (∀ c : HeapCall, c.valid st → ∃ st2, st.call c = some st2 ∧ st2.is_heap) ∧
    (∀ i, i < st.size → ∃ st2, st.remove i = some st2 ∧ st2.heap_index (st.heap i) = -1) ∧
    (0 < st.size → ∃ st2, st.get = some (st.heap 0, st2) ∧ st2.heap_index (st.heap 0) = -1) ∧
    (∀ m, st.reset.heap_index m = -1) := by
  have hok := h.ok
  refine ⟨hok.is_heap, hok, fun c hv => ?_, fun i hi => ?_, fun hn => ?_,
    (MGHeap.reset_ok st hok).2.2⟩
  · cases c with
    | reset => exact ⟨_, rfl, (MGHeap.reset_ok st hok).1.is_heap⟩
    | insert mg =>
      obtain ⟨st2, e, r, _⟩ := MGHeap.insert_ok st mg hok hv
      exact ⟨st2, e, r.is_heap⟩
    | get =>
      obtain ⟨st2, e, r, _⟩ := MGHeap.get_ok st hok hv
      exact ⟨st2, by simp [MGHeap.call, e], r.is_heap⟩
    | remove i =>
      obtain ⟨st2, e, r, _⟩ := MGHeap.remove_ok st i hok hv
      exact ⟨st2, e, r.is_heap⟩
    | change_value i v =>
      obtain ⟨st2, e, r, _⟩ := MGHeap.change_value_ok st i v hok hv
      exact ⟨st2, e, r.is_heap⟩
  · obtain ⟨st2, e, _, _, _, r, _⟩ := MGHeap.remove_ok st i hok hi
    exact ⟨st2, e, r⟩
  · obtain ⟨st2, e, _, _, _, r, _⟩ := MGHeap.get_ok st hok hn
    exact ⟨st2, e, r⟩

theorem heap_invariants_witness :
    heapDemo.is_heap ∧ heapDemo.OK ∧
    (∀ c : HeapCall, c.valid heapDemo → ∃ st2, heapDemo.call c = some st2 ∧ st2.is_heap) ∧
    (∀ i, i < heapDemo.size →
      ∃ st2, heapDemo.remove i = some st2 ∧ st2.heap_index (heapDemo.heap i) = -1) ∧
    (0 < heapDemo.size →
      ∃ st2, heapDemo.get = some (heapDemo.heap 0, st2) ∧
        st2.heap_index (heapDemo.heap 0) = -1) ∧
    (∀ m, heapDemo.reset.heap_index m = -1) :=
  heap_invariants heapDelta heapDemo heapDemo_reach

/-- C16, evaluation: the small heap `heapDemo`, reached by inserting the generators 1, 2, 3,
4 (deltas 9, 8, 7, 6), changing the delta of the head (generator 4) to 20, removing position 1
(generator 1), taking the head (generator 3) and inserting generator 5 (delta 5): it holds
the generators 5, 4, 2 in this order, with deltas 5, 20, 8 and heap indices 0, 1, 2, and the
generators 1 and 3 carry heap index -1. -/
theorem heapDemo_eval :
    heapDemo.size = 3 ∧ (heapDemo.heap 0, heapDemo.heap 1, heapDemo.heap 2) = (5, 4, 2) ∧
    (heapDemo.delta 5, heapDemo.delta 4, heapDemo.delta 2) = (5, 20, 8) ∧
    (heapDemo.heap_index 5, heapDemo.heap_index 4, heapDemo.heap_index 2) = (0, 1, 2) ∧
    (heapDemo.heap_index 1, heapDemo.heap_index 3) = (-1, -1) := by
  decide

/-! ## The claims on the constructor of `MoveGenerators` -/

/-- C17: given neighbour lists that begin with their vertex, are sorted by increasing cost and
hold the nearest vertices, and a symmetric cost, the constructor with `K = min(k, N-1)`
stores, for every vertex `i` and every `j` among the `K` nearest neighbours of `i`, the pair
of `i` and `j` at an even index, which is a base index of `i`; every pair stored comes from
such an `i` and `j`; no unordered pair occurs at two even indices; the move at the even
index `2m` is `(a, b)` with `a < b` and the move at index `2m + 1` is its twin `(b, a)`; the
base indices of a vertex are, without repetition, the even indices of the moves it is an
endpoint of; and every vertex has at least `K` base indices. -/
theorem constructor_pairs (I : Instance) (nb : Int → List Int) (k : Nat)
    (hnb : NbOK I nb (min k (I.vertices_num - 1))) (hsym : CostSym I) :
    (MoveGenerators.create I nb k).max_num_neighbors = min k (I.vertices_num - 1) ∧
    (∀ i, 0 ≤ i → i < (I.vertices_num : Int) → ∀ p, 1 ≤ p → p ≤ min k (I.vertices_num - 1) →
      ∃ m, 2 * m < (MoveGenerators.create I nb k).size ∧
        2 * m ∈ (MoveGenerators.create I nb k).base_move_indices_involving i ∧
        ((MoveGenerators.create I nb k).get (2 * m) = (i, (nb i).getD p 0) ∨
         (MoveGenerators.create I nb k).get (2 * m) = ((nb i).getD p 0, i))) ∧
    (∀ m, 2 * m < (MoveGenerators.create I nb k).size →
      ∃ i p, 0 ≤ i ∧ i < (I.vertices_num : Int) ∧ 1 ≤ p ∧ p ≤ min k (I.vertices_num - 1) ∧
        ((MoveGenerators.create I nb k).get (2 * m) = (i, (nb i).getD p 0) ∨
         (MoveGenerators.create I nb k).get (2 * m) = ((nb i).getD p 0, i))) ∧
    (∀ m m2, 2 * m < (MoveGenerators.create I nb k).size →
      2 * m2 < (MoveGenerators.create I nb k).size →
      ((MoveGenerators.create I nb k).get (2 * m) = (MoveGenerators.create I nb k).get (2 * m2) ∨
       (MoveGenerators.create I nb k).get (2 * m) =
        (((MoveGenerators.create I nb k).get (2 * m2)).2,
          ((MoveGenerators.create I nb k).get (2 * m2)).1)) → m = m2) ∧
    (∀ m, 2 * m < (MoveGenerators.create I nb k).size →
      2 * m + 1 < (MoveGenerators.create I nb k).size ∧
      ((MoveGenerators.create I nb k).get (2 * m)).1 <
        ((MoveGenerators.create I nb k).get (2 * m)).2 ∧
      (MoveGenerators.create I nb k).get (2 * m + 1) =
        (((MoveGenerators.create I nb k).get (2 * m)).2,
          ((MoveGenerators.create I nb k).get (2 * m)).1)) ∧
    (∀ v, ((MoveGenerators.create I nb k).base_move_indices_involving v).Nodup ∧
      ∀ idx, idx ∈ (MoveGenerators.create I nb k).base_move_indices_involving v ↔
        ∃ m, idx = 2 * m ∧ 2 * m < (MoveGenerators.create I nb k).size ∧
          (v = ((MoveGenerators.create I nb k).get idx).1 ∨
           v = ((MoveGenerators.create I nb k).get idx).2)) ∧
    (∀ v, 0 ≤ v → v < (I.vertices_num : Int) →
      min k (I.vertices_num - 1) ≤
        ((MoveGenerators.create I nb k).base_move_indices_involving v).length) := by
  have h := MoveGenerators.create_inv hnb hsym
  have hmnn := (MoveGenerators.create_size I nb k).2.2
  generalize MoveGenerators.create I nb k = mg at h hmnn
  have hlt : ∀ {idx : Nat} {x : Int × Int}, mg.moves[idx]? = some x → idx < mg.size :=
    fun e => (List.getElem?_eq_some.1 e).1
  refine ⟨hmnn, fun i hi0 hiN p hp1 hpK => ?_, fun m hm => ?_, fun m m2 hm hm2 e => ?_,
    fun m hm => ?_, fun v => ⟨h.base_nodup v, fun idx => ?_⟩, fun v hv0 hvN => ?_⟩
  · obtain ⟨_, m, hin, e⟩ := h.has hnb hi0 hiN hp1 hpK ⟨hi0, hiN, hp1, hpK⟩
    obtain ⟨m2, a, b, e1, e2, _⟩ := (h.base_iff i _).1 hin
    exact ⟨m, by rw [e1]; exact hlt e2, hin, e⟩
  · have tw := (h.twin hm).1
    have e := mg.getElem?_of_lt hm
    obtain ⟨x, q, ⟨d1, d2, d3, d4⟩, r⟩ := (h.present _ _ tw).1 ⟨m, e⟩
    refine ⟨x, q, d1, d2, d3, d4, ?_⟩
    rcases r with ⟨r1, r2⟩ | ⟨r1, r2⟩
    · left
      rw [r2, r1]
    · right
      rw [r2, r1]
  · have t1 := (h.twin hm).1
    have t2 := (h.twin hm2).1
    rcases e with e | e
    · have e1 := mg.getElem?_of_lt hm
      have e2 := mg.getElem?_of_lt hm2
      rw [← e] at e2
      rcases hx : mg.get (2 * m) with ⟨a, b⟩
      rw [hx] at e1 e2
      exact h.uniq m m2 a b e1 e2
    · rw [e] at t1
      exact absurd t1 (by simp only [not_lt]; exact le_of_lt t2)
  · obtain ⟨t1, t2, t3⟩ := h.twin hm
    exact ⟨t3, t1, t2⟩
  · rw [h.base_iff v idx]
    constructor
    · rintro ⟨m, a, b, e1, e2, e3⟩
      refine ⟨m, e1, hlt e2, ?_⟩
      rw [e1, MoveGenerators.get_of_getElem? e2]
      exact e3
    · rintro ⟨m, e1, hm, e3⟩
      rw [e1] at e3
      exact ⟨m, _, _, e1, mg.getElem?_of_lt hm, e3⟩
  · exact h.base_length hnb hv0 hvN (fun q q1 q2 => ⟨hv0, hvN, q1, q2⟩)

theorem constructor_pairs_witness :
    NbOK threeInstance threeNb (min 1 (threeInstance.vertices_num - 1)) ∧
    CostSym threeInstance ∧
    threeMoves.max_num_neighbors = min 1 (threeInstance.vertices_num - 1) ∧
    (∀ i, 0 ≤ i → i < (threeInstance.vertices_num : Int) → ∀ p, 1 ≤ p →
      p ≤ min 1 (threeInstance.vertices_num - 1) →
      ∃ m, 2 * m < threeMoves.size ∧ 2 * m ∈ threeMoves.base_move_indices_involving i ∧
        (threeMoves.get (2 * m) = (i, (threeNb i).getD p 0) ∨
         threeMoves.get (2 * m) = ((threeNb i).getD p 0, i))) ∧
    (∀ m, 2 * m < threeMoves.size →
      ∃ i p, 0 ≤ i ∧ i < (threeInstance.vertices_num : Int) ∧ 1 ≤ p ∧
        p ≤ min 1 (threeInstance.vertices_num - 1) ∧
        (threeMoves.get (2 * m) = (i, (threeNb i).getD p 0) ∨
         threeMoves.get (2 * m) = ((threeNb i).getD p 0, i))) ∧
    (∀ m m2, 2 * m < threeMoves.size → 2 * m2 < threeMoves.size →
      (threeMoves.get (2 * m) = threeMoves.get (2 * m2) ∨
       threeMoves.get (2 * m) = ((threeMoves.get (2 * m2)).2, (threeMoves.get (2 * m2)).1)) →
      m = m2) ∧
    (∀ m, 2 * m < threeMoves.size →
      2 * m + 1 < threeMoves.size ∧
      (threeMoves.get (2 * m)).1 < (threeMoves.get (2 * m)).2 ∧
      threeMoves.get (2 * m + 1) = ((threeMoves.get (2 * m)).2, (threeMoves.get (2 * m)).1)) ∧
    (∀ v, (threeMoves.base_move_indices_involving v).Nodup ∧
      ∀ idx, idx ∈ threeMoves.base_move_indices_involving v ↔
        ∃ m, idx = 2 * m ∧ 2 * m < threeMoves.size ∧
          (v = (threeMoves.get idx).1 ∨ v = (threeMoves.get idx).2)) ∧
    (∀ v, 0 ≤ v → v < (threeInstance.vertices_num : Int) →
      min 1 (threeInstance.vertices_num - 1) ≤
        (threeMoves.base_move_indices_involving v).length) :=
  ⟨threeNb_ok _ (by decide), threeInstance_sym,
    constructor_pairs threeInstance threeNb 1 (threeNb_ok _ (by decide)) threeInstance_sym⟩

/-- C17, evaluation: for the three vertices of `threeInstance` and `k = 1` the constructor
stores the pairs of 0 and 1 and of 1 and 2, each followed by its twin; the base indices of
the vertices 0, 1 and 2 are `[0]`, `[0, 2]` and `[2]`. -/
theorem threeMoves_eval :
    threeMoves.moves = [(0, 1), (1, 0), (1, 2), (2, 1)] ∧ threeMoves.edge_costs = [1, 2] ∧
    threeMoves.base_move_indices_involving 0 = [0] ∧
    threeMoves.base_move_indices_involving 1 = [0, 2] ∧
    threeMoves.base_move_indices_involving 2 = [2] := by
  decide

/-- C18, counterexample: for the three vertices of `threeInstance`, whose neighbour lists
`threeNb` are sorted and complete, and `k = 1`, the constructor stores four moves, more
than `N * K = 3 * 1`. -/
theorem constructor_size_exceeds :
    NbOK threeInstance threeNb (min 1 (threeInstance.vertices_num - 1)) ∧
    CostSym threeInstance ∧
    (MoveGenerators.create threeInstance threeNb 1).size = 4 ∧
    ¬ (MoveGenerators.create threeInstance threeNb 1).size ≤
      threeInstance.vertices_num * min 1 (threeInstance.vertices_num - 1) :=
  ⟨threeNb_ok _ (by decide), threeInstance_sym, by decide, by decide⟩

/-- C18, amended: for every instance with `N` vertices, all neighbour lists and every `k`,
the candidate-move array built by the constructor holds two entries per undirected pair and
at most `N * K` pairs, hence has size at most `2 * N * K`, where `K = min(k, N-1)`. -/
theorem constructor_size_bound (I : Instance) (nb : Int → List Int) (k : Nat) :
    (MoveGenerators.create I nb k).size = 2 * (MoveGenerators.create I nb k).edge_costs.length ∧
    (MoveGenerators.create I nb k).edge_costs.length ≤
      I.vertices_num * min k (I.vertices_num - 1) ∧
    (MoveGenerators.create I nb k).size ≤ 2 * I.vertices_num * min k (I.vertices_num - 1) := by
  obtain ⟨a1, a2, _⟩ := MoveGenerators.create_size I nb k
  refine ⟨a1, a2, ?_⟩
  rw [a1, Nat.mul_assoc]
  exact Nat.mul_le_mul_left 2 a2

/-! ## The claim on `set_active_percentage` -/

/-- C19: after any sequence of `set_active_percentage` calls that request, for vertices of
the instance, numbers of neighbours up to `K` (what `round(percentage[v] * K)` is for a
percentage between 0 and 1), `num v` being the number last requested for `v`: the base
indices of `v` are in the order of increasing edge cost and a move involving `v` is active
in the role of `v` exactly when it is among the first `num v` of them; the list
`get_move_generator_indices_involving_1st(v)` holds exactly the moves involving `v` that are
active in at least one of their two endpoint roles, each by its index with first vertex `v`
and none with a repeated second endpoint; and `(v, j)` is in the list of `v` exactly when
`(j, v)` is in the list of `j`. -/
theorem active_lists (I : Instance) (nb : Int → List Int) (k : Nat)
    (hnb : NbOK I nb (min k (I.vertices_num - 1))) (hsym : CostSym I) (mg : MoveGenerators)
    (num : Int → Nat) (h : ActiveReach I nb k mg num) :
    (∀ v, 0 ≤ v → v < (I.vertices_num : Int) →
      (mg.base_move_indices_involving v).Sorted
        (fun a b => mg.get_edge_cost a ≤ mg.get_edge_cost b)) ∧
    (∀ v, mg.current_num_neighbors v = num v ∧
      num v ≤ (mg.base_move_indices_involving v).length) ∧
    (∀ v b, b ∈ mg.base_move_indices_involving v →
      (mg.is_active_in b v = true ↔
        ∃ n, n < num v ∧ (mg.base_move_indices_involving v)[n]? = some b)) ∧
    (∀ v idx, idx ∈ mg.get_move_generator_indices_involving_1st v ↔
      ∃ b ∈ mg.base_move_indices_involving v, idx = mg.orient v b ∧
        (mg.is_active_in b (mg.get b).1 = true ∨ mg.is_active_in b (mg.get b).2 = true)) ∧
    (∀ v idx, idx ∈ mg.get_move_generator_indices_involving_1st v →
      idx < mg.size ∧ (mg.get idx).1 = v) ∧
    (∀ v, ((mg.get_move_generator_indices_involving_1st v).map
      (fun idx => (mg.get idx).2)).Nodup) ∧
    (∀ v j, (∃ idx ∈ mg.get_move_generator_indices_involving_1st v, mg.get idx = (v, j)) ↔
      (∃ idx ∈ mg.get_move_generator_indices_involving_1st j, mg.get idx = (j, v))) := by
  obtain ⟨hs, ha⟩ := h.active_ok hnb hsym
  have hP := (MoveGenerators.create_inv hnb hsym).same hs
  have hlist : ∀ v, mg.get_move_generator_indices_involving_1st v = mg.oriented v := ha.lists
  refine ⟨fun v v0 vN => ?_, fun v => ⟨ha.current v, ha.bound v⟩,
    fun v b hb => ha.role_iff hP hb, fun v idx => ?_, fun v idx hin => ?_, fun v => ?_,
    fun v j => ?_⟩
  · have hsort := MoveGenerators.sort_loop_sorted I
      (MoveGenerators.pair_loops I nb (MoveGenerators.init I k)) v v0 vN
    have e : mg.get_edge_cost = (MoveGenerators.create I nb k).get_edge_cost := by
      funext a
      unfold MoveGenerators.get_edge_cost
      rw [hs.2.1]
    rw [hs.2.2.1, e]
    exact hsort
  · rw [hlist]
    unfold MoveGenerators.oriented
    rw [List.mem_map]
    constructor
    · rintro ⟨b, hb, e⟩
      rw [List.mem_filter] at hb
      exact ⟨b, hb.1, e.symm, (hP.any_iff hb.1).1 (by simpa using hb.2)⟩
    · rintro ⟨b, hb, e, hact⟩
      exact ⟨b, List.mem_filter.2 ⟨hb, by simpa using (hP.any_iff hb).2 hact⟩, e.symm⟩
  · rw [hlist] at hin
    obtain ⟨h1, h2, _⟩ := (hP.mem_oriented v idx).1 hin
    exact ⟨h1, h2⟩
  · rw [hlist]
    exact hP.oriented_nodup v
  · rw [hlist, hlist]
    exact ⟨hP.oriented_twin, hP.oriented_twin⟩

theorem threeActive_reach : ActiveReach threeInstance threeNb 1 threeActive threeNum := by
  refine ActiveReach.step _ _ _ _ (ActiveReach.step _ _ _ _ ActiveReach.init ?_) ?_
  · intro v hv
    simp only [List.mem_cons, List.mem_singleton, List.not_mem_nil, or_false] at hv
    rcases hv with e | e <;> subst e <;> decide
  · intro v hv
    simp only [List.mem_cons, List.mem_singleton, List.not_mem_nil, or_false] at hv
    subst hv
    decide

theorem active_lists_witness :
    NbOK threeInstance threeNb (min 1 (threeInstance.vertices_num - 1)) ∧
    CostSym threeInstance ∧ ActiveReach threeInstance threeNb 1 threeActive threeNum ∧
    (∀ v, 0 ≤ v → v < (threeInstance.vertices_num : Int) →
      (threeActive.base_move_indices_involving v).Sorted
        (fun a b => threeActive.get_edge_cost a ≤ threeActive.get_edge_cost b)) ∧
    (∀ v, threeActive.current_num_neighbors v = threeNum v ∧
      threeNum v ≤ (threeActive.base_move_indices_involving v).length) ∧
    (∀ v b, b ∈ threeActive.base_move_indices_involving v →
      (threeActive.is_active_in b v = true ↔
        ∃ n, n < threeNum v ∧ (threeActive.base_move_indices_involving v)[n]? = some b)) ∧
    (∀ v idx, idx ∈ threeActive.get_move_generator_indices_involving_1st v ↔
      ∃ b ∈ threeActive.base_move_indices_involving v, idx = threeActive.orient v b ∧
        (threeActive.is_active_in b (threeActive.get b).1 = true ∨
          threeActive.is_active_in b (threeActive.get b).2 = true)) ∧
    (∀ v idx, idx ∈ threeActive.get_move_generator_indices_involving_1st v →
      idx < threeActive.size ∧ (threeActive.get idx).1 = v) ∧
    (∀ v, ((threeActive.get_move_generator_indices_involving_1st v).map
      (fun idx => (threeActive.get idx).2)).Nodup) ∧
    (∀ v j,
      (∃ idx ∈ threeActive.get_move_generator_indices_involving_1st v,
        threeActive.get idx = (v, j)) ↔
      (∃ idx ∈ threeActive.get_move_generator_indices_involving_1st j,
        threeActive.get idx = (j, v))) :=
  ⟨threeNb_ok _ (by decide), threeInstance_sym, threeActive_reach,
    active_lists threeInstance threeNb 1 (threeNb_ok _ (by decide)) threeInstance_sym
      threeActive threeNum threeActive_reach⟩

/-- C19, evaluation: in `threeActive` vertex 0 requests one neighbour and the vertices 1 and
2 none; the move of the vertices 0 and 1 is active in the role of 0 only, and it is in the
list of 0 as `(0, 1)`, index 0, and in the list of 1 as `(1, 0)`, index 1; the list of 2 is
empty. -/
theorem threeActive_eval :
    threeActive.get_move_generator_indices_involving_1st 0 = [0] ∧
    threeActive.get_move_generator_indices_involving_1st 1 = [1] ∧
    threeActive.get_move_generator_indices_involving_1st 2 = [] ∧
    (threeActive.current_num_neighbors 0, threeActive.current_num_neighbors 1,
      threeActive.current_num_neighbors 2) = (1, 0, 0) ∧
    threeActive.is_active_in 0 0 = true ∧ threeActive.is_active_in 0 1 = false := by
  decide

/-! ## The claim on `OneOneExchange` -/

theorem lineThree_rep :
    Rep lineInstance lineThree lineThreeA ∧ CostOK lineInstance lineThree lineThreeA := by
  obtain ⟨h1, h2, _⟩ := insert_vertex_ok2 false lineTwo_rep.1 lineTwo_rep.2
    (show lineTwoA 1 ~r (0 :: [1, 2]) from ⟨1, by decide⟩)
    (show (3 : Int) ∉ lineTwoA 1 by decide) (by decide) (by decide)
  exact ⟨h1, h2⟩

theorem lineSplit_rep :
    Rep lineInstance lineSplit lineSplitA ∧ CostOK lineInstance lineSplit lineSplitA := by
  obtain ⟨h1, h2, _⟩ := insert_vertex_ok2 false lineBoth_rep.1 lineBoth_rep.2
    (show lineBothA 2 ~r (0 :: [2]) from ⟨0, by decide⟩)
    (show (3 : Int) ∉ lineBothA 2 by decide) (by decide) (by decide)
  exact ⟨h1, h2⟩

theorem lineSplit_depot : ∀ r, lineSplitA r ≠ [] → (0 : Int) ∈ lineSplitA r := by
  intro r hr
  unfold lineSplitA lineBothA lineOneA at hr ⊢
  by_cases e2 : r = 2
  · simp [upd, e2]
  · by_cases e1 : r = 1
    · simp [upd, e1]
    · simp [upd, e1, e2] at hr

/-- C20: for a consistent solution (described by the cycles `A`, every route with its
depot, the stored cost the sum of the arc costs) and a move generator `(i, j)` of two
vertices of the solution for which `is_feasible` holds, whether `i` and `j` are in one route
or in two, and also when `i`, `j` or the predecessor of `j` is the depot: after `execute`
the solution is consistent again, the routes of `i` and `j` are the old ones with `i` and
the predecessor of `j` exchanged and the other routes are unchanged, the stored total cost
has changed by exactly `compute_cost(solution, move)` of the solution before the move, and
this value is the delta that `compute_cost(move, icache, jcache)` and the first component of
`compute_cost_pair` give from the caches, whose second component is `compute_cost` of the
twin move. -/
theorem one_one_exchange_spec (I : Instance) (hsym : CostSym I) (s : Solution)
    (A : Nat → List Int) (hR : Rep I s A) (hC : CostOK I s A)
    (hdep : ∀ r, A r ≠ [] → (0 : Int) ∈ A r) (i j : Int) (hij : i ≠ j)
    (hi : i ≠ 0 → (s.customers_list i).route_ptr ≠ 0)
    (hj : j ≠ 0 → (s.customers_list j).route_ptr ≠ 0)
    (hf : OneOneExchange.is_feasible I s i j = true) :
    (∃ B, Rep I (OneOneExchange.execute I s i j) B ∧
      CostOK I (OneOneExchange.execute I s i j) B ∧ (∀ r, B r ≠ [] → (0 : Int) ∈ B r) ∧
      (∀ r, B r ~r
        (if r = s.get_route_index_fallback i j ∨ r = s.get_route_index_fallback j i then
          (A r).map (fun v =>
            if v = i then s.get_prev_vertex (s.get_route_index_fallback j i) j
            else if v = s.get_prev_vertex (s.get_route_index_fallback j i) j then i else v)
        else A r))) ∧
    (OneOneExchange.execute I s i j).solution_cost =
      s.solution_cost + OneOneExchange.compute_cost I s i j ∧
    OneOneExchange.compute_cost_cached I (I.cost i j) (OneOneExchange.cache_of s i j)
      (OneOneExchange.cache_of s j i) = OneOneExchange.compute_cost I s i j ∧
    OneOneExchange.compute_cost_pair I (I.cost i j) (OneOneExchange.cache_of s i j)
      (OneOneExchange.cache_of s j i) =
      (OneOneExchange.compute_cost I s i j, OneOneExchange.compute_cost I s j i) := by
  obtain ⟨B, h1, h2, h3, h4, h5⟩ := execute_spec hR hC hdep hij hi hj hf
  obtain ⟨c1, c2⟩ := cached_cost_eq hsym hR hdep hij hi hj
  exact ⟨⟨B, h1, h2, h3, h4⟩, h5, c1, c2⟩

theorem one_one_exchange_spec_witness :
    OneOneExchange.is_feasible lineInstance lineSplit 1 3 = true ∧
    (∃ B, Rep lineInstance (OneOneExchange.execute lineInstance lineSplit 1 3) B ∧
      CostOK lineInstance (OneOneExchange.execute lineInstance lineSplit 1 3) B ∧
      (∀ r, B r ≠ [] → (0 : Int) ∈ B r) ∧
      (∀ r, B r ~r
        (if r = lineSplit.get_route_index_fallback 1 3 ∨
            r = lineSplit.get_route_index_fallback 3 1 then
          (lineSplitA r).map (fun v =>
            if v = 1 then lineSplit.get_prev_vertex (lineSplit.get_route_index_fallback 3 1) 3
            else if v = lineSplit.get_prev_vertex (lineSplit.get_route_index_fallback 3 1) 3
              then 1 else v)
        else lineSplitA r))) ∧
    (OneOneExchange.execute lineInstance lineSplit 1 3).solution_cost =
      lineSplit.solution_cost + OneOneExchange.compute_cost lineInstance lineSplit 1 3 ∧
    OneOneExchange.compute_cost_cached lineInstance (lineInstance.cost 1 3)
      (OneOneExchange.cache_of lineSplit 1 3) (OneOneExchange.cache_of lineSplit 3 1) =
      OneOneExchange.compute_cost lineInstance lineSplit 1 3 ∧
    OneOneExchange.compute_cost_pair lineInstance (lineInstance.cost 1 3)
      (OneOneExchange.cache_of lineSplit 1 3) (OneOneExchange.cache_of lineSplit 3 1) =
      (OneOneExchange.compute_cost lineInstance lineSplit 1 3,
        OneOneExchange.compute_cost lineInstance lineSplit 3 1) :=
  ⟨by decide, one_one_exchange_spec lineInstance lineInstance_sym lineSplit lineSplitA
    lineSplit_rep.1 lineSplit_rep.2 lineSplit_depot 1 3 (by decide) (by decide) (by decide)
    (by decide)⟩

/-- C20, evaluation: on `lineSplit` (routes `depot, 1` and `depot, 2, 3`, cost 16) the move
`(1, 3)` is feasible, `compute_cost` is 6 and `execute` leaves the routes `depot, 2` and
`depot, 1, 3` with cost 22; on `lineThree` (route `depot, 1, 2, 3`) the move `(1, depot)`,
whose second vertex is the depot, is feasible and `execute` leaves the route
`depot, 3, 2, 1`. -/
theorem one_one_exchange_eval :
    OneOneExchange.compute_cost lineInstance lineSplit 1 3 = 6 ∧
    lineSplit.solution_cost = 16 ∧
    (OneOneExchange.execute lineInstance lineSplit 1 3).solution_cost = 22 ∧
    (OneOneExchange.execute lineInstance lineSplit 1 3).get_next_vertex 1 0 = 2 ∧
    (OneOneExchange.execute lineInstance lineSplit 1 3).get_next_vertex 1 2 = 0 ∧
    (OneOneExchange.execute lineInstance lineSplit 1 3).get_next_vertex 2 0 = 1 ∧
    (OneOneExchange.execute lineInstance lineSplit 1 3).get_next_vertex 2 1 = 3 ∧
    (OneOneExchange.execute lineInstance lineSplit 1 3).get_next_vertex 2 3 = 0 ∧
    OneOneExchange.is_feasible lineInstance lineThree 1 0 = true ∧
    (OneOneExchange.execute lineInstance lineThree 1 0).get_next_vertex 1 0 = 3 ∧
    (OneOneExchange.execute lineInstance lineThree 1 0).get_next_vertex 1 3 = 2 ∧
    (OneOneExchange.execute lineInstance lineThree 1 0).get_next_vertex 1 2 = 1 ∧
    (OneOneExchange.execute lineInstance lineThree 1 0).get_next_vertex 1 1 = 0 := by
  decide
theorem lineSplit_cap : ∀ r, loadOf lineInstance (lineSplitA r) ≤ lineInstance.vehicle_capacity := by
  intro r
  unfold lineSplitA lineBothA lineOneA
  by_cases e2 : r = 2
  · subst e2; decide
  · by_cases e1 : r = 1
    · subst e1; decide
    · simp [upd, e1, e2, lineInstance]

theorem lineSplit_full : ∀ r, lineSplitA r ≠ [] → ∃ c ∈ lineSplitA r, c ≠ 0 := by
  intro r hr
  unfold lineSplitA lineBothA lineOneA at hr ⊢
  by_cases e2 : r = 2
  · subst e2; exact ⟨2, by decide, by decide⟩
  · by_cases e1 : r = 1
    · subst e1; exact ⟨1, by decide, by decide⟩
    · simp [upd, e1, e2] at hr

/-- C21: for a consistent solution (described by the cycles `A`, every route with its depot,
the stored cost the sum of the arc costs) in which every route load is at most the vehicle
capacity and every present route serves a customer, and a move `(i, j)` of two vertices of
the solution accepted by `OneOneExchange::is_feasible`: the solution after
`OneOneExchange::execute` is consistent again, it serves the same vertices, every customer
is in exactly one route, every route load (of the cycle, and stored in the route node) is at
most the vehicle capacity, and every present route serves at least one customer. -/
theorem one_one_exchange_feasible (I : Instance) (s : Solution) (A : Nat → List Int)
    (hR : Rep I s A) (hC : CostOK I s A) (hdep : ∀ r, A r ≠ [] → (0 : Int) ∈ A r)
    (hcap : ∀ r, loadOf I (A r) ≤ I.vehicle_capacity)
    (hfull : ∀ r, A r ≠ [] → ∃ c ∈ A r, c ≠ 0) (i j : Int) (hij : i ≠ j)
    (hi : i ≠ 0 → (s.customers_list i).route_ptr ≠ 0)
    (hj : j ≠ 0 → (s.customers_list j).route_ptr ≠ 0)
    (hf : OneOneExchange.is_feasible I s i j = true) :
    ∃ B, Rep I (OneOneExchange.execute I s i j) B ∧
      CostOK I (OneOneExchange.execute I s i j) B ∧ (∀ r, B r ≠ [] → (0 : Int) ∈ B r) ∧
      (∀ v, (∃ r, v ∈ B r) ↔ ∃ r, v ∈ A r) ∧
      (∀ v, v ≠ 0 → ∀ r1 r2, v ∈ B r1 → v ∈ B r2 → r1 = r2) ∧
      (∀ r, loadOf I (B r) ≤ I.vehicle_capacity) ∧
      (∀ r, (OneOneExchange.execute I s i j).is_route_in_solution r = true →
        (OneOneExchange.execute I s i j).get_route_load r ≤ I.vehicle_capacity ∧
        ∃ c ∈ B r, c ≠ 0) := by
  obtain ⟨B, h1, h2, h3, h4, h5, h6⟩ := execute_partition hR hC hdep hcap hfull hij hi hj hf
  refine ⟨B, h1, h2, h3, h4, ?_, h5, ?_⟩
  · intro v hv r1 r2 m1 m2
    exact (h1.route_of_mem hv m1).1.symm.trans (h1.route_of_mem hv m2).1
  · intro r hr
    have hB : B r ≠ [] := (h1.routes r).present_iff.2 hr
    refine ⟨?_, h6 r hB⟩
    have := (h1.routes r).load hB
    unfold Solution.get_route_load
    rw [this]
    exact h5 r

theorem one_one_exchange_feasible_witness :
    OneOneExchange.is_feasible lineInstance lineSplit 1 3 = true ∧
    ∃ B, Rep lineInstance (OneOneExchange.execute lineInstance lineSplit 1 3) B ∧
      CostOK lineInstance (OneOneExchange.execute lineInstance lineSplit 1 3) B ∧
      (∀ r, B r ≠ [] → (0 : Int) ∈ B r) ∧
      (∀ v, (∃ r, v ∈ B r) ↔ ∃ r, v ∈ lineSplitA r) ∧
      (∀ v, v ≠ 0 → ∀ r1 r2, v ∈ B r1 → v ∈ B r2 → r1 = r2) ∧
      (∀ r, loadOf lineInstance (B r) ≤ lineInstance.vehicle_capacity) ∧
      (∀ r, (OneOneExchange.execute lineInstance lineSplit 1 3).is_route_in_solution r = true →
        (OneOneExchange.execute lineInstance lineSplit 1 3).get_route_load r ≤
          lineInstance.vehicle_capacity ∧
        ∃ c ∈ B r, c ≠ 0) :=
  ⟨by decide, one_one_exchange_feasible lineInstance lineSplit lineSplitA
    lineSplit_rep.1 lineSplit_rep.2 lineSplit_depot lineSplit_cap lineSplit_full 1 3
    (by decide) (by decide) (by decide) (by decide)⟩

theorem lineOne_mutated : Mutated lineInstance 5 lineOne lineOneA :=
  Mutated.build false 1 (Mutated.fresh 5) (by decide) (by decide) (by decide) (by decide)

theorem lineOne_full : ∀ r, lineOneA r ≠ [] → ∃ c ∈ lineOneA r, c ≠ 0 := by
  intro r hr
  unfold lineOneA at hr ⊢
  by_cases e1 : r = 1
  · subst e1; exact ⟨1, by decide, by decide⟩
  · simp [upd, e1] at hr

/-- C30: in every state reached from the empty solution by the mutators of the class
(described by the cycles `A`; every customer is then in at most one route), if every present
route serves at least one customer and customer `c` is unserved, the route pool is not
empty; `build_one_customer_route(c)` obtains a route index between 1 and the number of
vertices that is not in the solution, and the solution with the new route is consistent. -/
theorem pool_never_exhausted (I : Instance) (hsym : CostSym I) (fuel : Nat)
    (hf : I.vertices_num < fuel) (s : Solution) (A : Nat → List Int) (hm : Mutated I fuel s A)
    (hfull : ∀ r, A r ≠ [] → ∃ c ∈ A r, c ≠ 0) (c : Int) (hc0 : 0 < c)
    (hcN : c < (I.vertices_num : Int)) (hun : s.is_customer_in_solution c = false)
    (ra : Bool) :
    s.routes_pool.is_empty = false ∧
    0 < (Solution.build_one_customer_route I s ra c).1 ∧
    (Solution.build_one_customer_route I s ra c).1 ≤ I.vertices_num ∧
    s.is_route_in_solution (Solution.build_one_customer_route I s ra c).1 = false ∧
    A (Solution.build_one_customer_route I s ra c).1 = [] ∧
    Rep I (Solution.build_one_customer_route I s ra c).2
      (upd A (Solution.build_one_customer_route I s ra c).1 [0, c]) := by
  have hR := (Mutated.inv hsym hf hm).1
  obtain ⟨hP, hmax⟩ := Mutated.pool_full hsym hf hm
  have hptr : (s.customers_list c).route_ptr = 0 := by
    simpa [Solution.is_customer_in_solution] using hun
  have hno : ∀ r, c ∉ A r := fun r h => by
    have := hR.route_of_mem (ne_of_gt hc0) h
    exact this.2 (this.1.symm.trans hptr)
  have hpool := hR.pool_nonempty hP hmax hfull hc0 hcN hno
  obtain ⟨a1, a2, a3⟩ := hR.pool_absent _ (le_refl _) hpool
  rw [Solution.build_route_eq]
  refine ⟨?_, a2, by omega, ?_, a1, ?_⟩
  · simp only [FixedSizeValueStack.is_empty, decide_eq_false_iff_not]
    omega
  · have := (hR.routes (s.routes_pool.array s.routes_pool.begin)).present_iff
    rw [a1] at this
    simpa [Solution.is_route_in_solution] using this
  · rw [← Solution.build_route_eq I s ra c]
    exact build_rep ra hsym hR ⟨hc0, hcN⟩ hptr hpool

theorem pool_never_exhausted_witness :
    lineOne.routes_pool.is_empty = false ∧
    0 < (Solution.build_one_customer_route lineInstance lineOne true 2).1 ∧
    (Solution.build_one_customer_route lineInstance lineOne true 2).1 ≤
      lineInstance.vertices_num ∧
    lineOne.is_route_in_solution
      (Solution.build_one_customer_route lineInstance lineOne true 2).1 = false ∧
    lineOneA (Solution.build_one_customer_route lineInstance lineOne true 2).1 = [] ∧
    Rep lineInstance (Solution.build_one_customer_route lineInstance lineOne true 2).2
      (upd lineOneA (Solution.build_one_customer_route lineInstance lineOne true 2).1
        [0, 2]) :=
  pool_never_exhausted lineInstance lineInstance_sym 5 (by decide) lineOne lineOneA
    lineOne_mutated lineOne_full 2 (by decide) (by decide) (by decide) true

theorem lineEmpty_rep : Rep lineInstance lineEmpty (fun _ => []) := fresh_rep lineInstance 5

theorem lineEmpty_cache : lineEmpty.cache.Holds [] := by
  have : lineEmpty.cache = LRUCache.create 5 := (Solution.fresh_fields lineInstance 5).2.2.2.2.2.1
  rw [this]
  exact LRUCache.create_holds 5

theorem lineNb_range : ∀ i : Int, 0 < i → i < (lineInstance.vertices_num : Int) →
    ∀ j ∈ lineNb i, j < (lineInstance.vertices_num : Int) := by
  intro i h0 h1
  have h2 : i < 4 := h1
  interval_cases i <;> decide

theorem lineInstance_demand : ∀ c : Int, 0 < c → c < (lineInstance.vertices_num : Int) →
    0 < lineInstance.demand c ∧ lineInstance.demand c ≤ lineInstance.vehicle_capacity := by
  intro c h0 h1
  have h2 : c < 4 := h1
  interval_cases c <;> decide

/-- C25, counterexample: in `lineInstance` every customer has the demand 2, positive and at
most the capacity 10; with the neighbour limit `-1` the number of savings is `3 * (-1)`,
`savings.reserve` throws `std::length_error`, and `clarke_and_wright` produces no solution,
whatever the fuel. -/
theorem clarke_and_wright_negative_limit :
    (∀ c : Int, 0 < c → c < (lineInstance.vertices_num : Int) →
      0 < lineInstance.demand c ∧ lineInstance.demand c ≤ lineInstance.vehicle_capacity) ∧
    Savings.savings_num lineInstance (-1) = -3 ∧
    ∀ fuel, Savings.clarke_and_wright lineInstance lineNb lineEmpty 1 1 (-1) fuel = none := by
  refine ⟨lineInstance_demand, by decide, fun fuel => ?_⟩
  exact Savings.clarke_and_wright_throws lineInstance lineNb _ 1 1 (by decide) fuel

/-- C25, amended: for every instance with a depot, symmetric costs, neighbour lists of
vertices and customer demands that are positive and at most the vehicle capacity, every weight
`lambda = lnum / lden` and every neighbour limit that is not negative and for which the
number of savings `customers_num * min(customers_num - 1, neighbors_num)` fits the type
`int` (so that `savings.reserve` returns), `clarke_and_wright` run on a consistent solution
object returns (given fuel for the loops) a feasible solution: it is consistent, every
customer belongs to exactly one route, which is present, every present route has its depot
and at least one customer and is not empty for `is_route_empty`, its stored load is the sum
of the demands of its customers and at most the vehicle capacity, and the stored cost is
the sum of the arc costs of the routes. -/
theorem clarke_and_wright_feasible (I : Instance) (hsym : CostSym I) (hN : 1 ≤ I.vertices_num)
    (nb : Int → List Int)
    (hnb : ∀ i : Int, 0 < i → i < (I.vertices_num : Int) → ∀ j ∈ nb i, j < (I.vertices_num : Int))
    (hdem : ∀ c : Int, 0 < c → c < (I.vertices_num : Int) →
      0 < I.demand c ∧ I.demand c ≤ I.vehicle_capacity)
    (s : Solution) (A : Nat → List Int) (hR : Rep I s A)
    (hmax : s.max_number_routes = I.vertices_num + 1) (l : List Int) (hc : s.cache.Holds l)
    (fuel : Nat) (hf : l.length < fuel) (hf2 : I.vertices_num ≤ fuel)
    (lnum lden neighbors_num : Int) (hlim : 0 ≤ neighbors_num)
    (hfit : Savings.savings_num I neighbors_num < 2147483648) :
    ∃ s1 B, Savings.clarke_and_wright I nb s lnum lden neighbors_num fuel = some s1 ∧
      Rep I s1 B ∧
      (∀ c : Int, 0 < c → c < (I.vertices_num : Int) →
        ∃ r, s1.is_route_in_solution r = true ∧ c ∈ B r ∧ ∀ r2, c ∈ B r2 → r2 = r) ∧
      (∀ r, s1.is_route_in_solution r = true →
        (0 : Int) ∈ B r ∧ (∃ c ∈ B r, c ≠ 0) ∧ s1.is_route_empty r = false ∧
        s1.get_route_load r = loadOf I (B r) ∧ s1.get_route_load r ≤ I.vehicle_capacity) ∧
      s1.solution_cost = ∑ r in Finset.range s1.max_number_routes, cycCost I.cost (B r) := by
  obtain ⟨s1, B, e1, h1, -⟩ := Savings.clarke_and_wright_ok hsym hN hnb
    (fun c c0 c1 => (hdem c c0 c1).2) hR hmax hc hf hf2 lnum lden neighbors_num hlim hfit
  refine ⟨s1, B, e1, h1.rep, fun c c0 c1 => ?_, fun r hr => ?_, h1.cost⟩
  · obtain ⟨r, hr⟩ := h1.served c c0 c1
    refine ⟨r, (h1.rep.routes r).present_iff.1 (List.ne_nil_of_mem hr), hr, fun r2 h2 => ?_⟩
    exact (h1.rep.route_of_mem (ne_of_gt c0) h2).1.symm.trans
      (h1.rep.route_of_mem (ne_of_gt c0) hr).1
  · have hB : B r ≠ [] := (h1.rep.routes r).present_iff.2 hr
    obtain ⟨t, ht, htn⟩ := h1.shape r hB
    have hload : s1.get_route_load r = loadOf I (B r) := (h1.rep.routes r).load hB
    have hnd := (h1.rep.routes r).nodup
    rw [ht] at hnd
    obtain ⟨x, t2, rfl⟩ : ∃ x t2, t = x :: t2 := by
      cases t with
      | nil => exact absurd rfl htn
      | cons x t2 => exact ⟨x, t2, rfl⟩
    have hx0 : x ≠ 0 := fun e => (List.nodup_cons.1 hnd).1 (by rw [← e]; simp)
    have hcust : ∃ c ∈ B r, c ≠ 0 := ⟨x, by rw [ht]; simp, hx0⟩
    have hpos : 0 < loadOf I (B r) := by
      refine loadOf_pos (B r) (fun v hv hv0 => ?_) hcust
      have := (h1.rep.routes r).range v hv
      exact (hdem v (by omega) this.2).1
    refine ⟨by rw [ht]; simp, hcust, ?_, hload, by rw [hload]; exact h1.cap r hB⟩
    have hl2 : (s1.routes_list r).load = loadOf I (B r) := hload
    simp only [Solution.is_route_empty, decide_eq_false_iff_not, hl2]
    omega

theorem clarke_and_wright_feasible_witness :
    (0 : Int) ≤ 2 ∧ Savings.savings_num lineInstance 2 < 2147483648 ∧
    ∃ s1 B, Savings.clarke_and_wright lineInstance lineNb lineEmpty 1 1 2 5 = some s1 ∧
      Rep lineInstance s1 B ∧
      (∀ c : Int, 0 < c → c < (lineInstance.vertices_num : Int) →
        ∃ r, s1.is_route_in_solution r = true ∧ c ∈ B r ∧ ∀ r2, c ∈ B r2 → r2 = r) ∧
      (∀ r, s1.is_route_in_solution r = true →
        (0 : Int) ∈ B r ∧ (∃ c ∈ B r, c ≠ 0) ∧ s1.is_route_empty r = false ∧
        s1.get_route_load r = loadOf lineInstance (B r) ∧
        s1.get_route_load r ≤ lineInstance.vehicle_capacity) ∧
      s1.solution_cost =
        ∑ r in Finset.range s1.max_number_routes, cycCost lineInstance.cost (B r) :=
  ⟨by decide, by decide,
    clarke_and_wright_feasible lineInstance lineInstance_sym (by decide) lineNb lineNb_range
      lineInstance_demand lineEmpty (fun _ => []) lineEmpty_rep (by decide) [] lineEmpty_cache 5
      (by decide) (by decide) 1 1 2 (by decide) (by decide)⟩

theorem singles_cost_eq (I : Instance) : ∀ n : Nat,
    Savings.singles_cost I n = 2 * ∑ m in Finset.range n, I.cost 0 ((m : Int) + 1)
  | 0 => by simp [Savings.singles_cost]
  | n + 1 => by
    rw [Savings.singles_cost, singles_cost_eq I n, Finset.sum_range_succ]
    ring

theorem lineInstance_triangle : ∀ a b : Int, 0 < a → a < (lineInstance.vertices_num : Int) →
    0 < b → b < (lineInstance.vertices_num : Int) →
    lineInstance.cost a b ≤ lineInstance.cost a 0 + lineInstance.cost 0 b := by
  intro a b a0 a1 b0 b1
  have a2 : a < 4 := a1
  have b2 : b < 4 := b1
  interval_cases a <;> interval_cases b <;> decide

/-- C24, counterexample: `roundInstance` has the rounded Euclidean costs of a depot at
`(0, 0)` and customers at `(1, 1)` and `(-1, -1)`, demands within the capacity; with
`lambda = 1` and two neighbours `clarke_and_wright` merges the two routes, whose saving
`1 + 1 - 3` is negative, and returns a solution of cost 5, while twice the sum of the costs
from the depot is 4. With the neighbour limit `-1` the number of savings is `2 * (-1)`,
`savings.reserve` throws `std::length_error`, and no solution is produced, whatever the
fuel. -/
theorem clarke_and_wright_cost_exceeds :
    roundInstance.demand 1 ≤ roundInstance.vehicle_capacity ∧
    roundInstance.demand 2 ≤ roundInstance.vehicle_capacity ∧
    (Savings.clarke_and_wright roundInstance roundNb (Solution.fresh roundInstance 5) 1 1 2 5).map
      Solution.get_cost = some 5 ∧
    2 * ∑ m in Finset.range (roundInstance.vertices_num - 1),
      roundInstance.cost 0 ((m : Int) + 1) = 4 ∧
    Savings.savings_num roundInstance (-1) = -2 ∧
    ∀ fuel, Savings.clarke_and_wright roundInstance roundNb (Solution.fresh roundInstance 5)
      1 1 (-1) fuel = none := by
  refine ⟨by decide, by decide, by decide, by decide, by decide, fun fuel => ?_⟩
  exact Savings.clarke_and_wright_throws roundInstance roundNb _ 1 1 (by decide) fuel

/-- C24, amended: for every instance with a depot, symmetric costs, neighbour lists of
vertices and customer demands at most the vehicle capacity, whose costs satisfy
`cost(i, j) <= cost(i, depot) + cost(depot, j)` for all customers `i` and `j`, every weight
`lambda = lnum / lden` and every neighbour limit that is not negative (and for which the
number of savings `customers_num * min(customers_num - 1, neighbors_num)` fits the type
`int`): `clarke_and_wright` run on a consistent solution object returns a solution whose
total cost is at most twice the sum over the customers of their cost from the depot. -/
theorem clarke_and_wright_cost_bound (I : Instance) (hsym : CostSym I)
    (hN : 1 ≤ I.vertices_num) (nb : Int → List Int)
    (hnb : ∀ i : Int, 0 < i → i < (I.vertices_num : Int) → ∀ j ∈ nb i, j < (I.vertices_num : Int))
    (hdem : ∀ c : Int, 0 < c → c < (I.vertices_num : Int) → I.demand c ≤ I.vehicle_capacity)
    (htri : ∀ a b : Int, 0 < a → a < (I.vertices_num : Int) → 0 < b →
      b < (I.vertices_num : Int) → I.cost a b ≤ I.cost a 0 + I.cost 0 b)
    (s : Solution) (A : Nat → List Int) (hR : Rep I s A)
    (hmax : s.max_number_routes = I.vertices_num + 1) (l : List Int) (hc : s.cache.Holds l)
    (fuel : Nat) (hf : l.length < fuel) (hf2 : I.vertices_num ≤ fuel)
    (lnum lden neighbors_num : Int) (hlim : 0 ≤ neighbors_num)
    (hfit : Savings.savings_num I neighbors_num < 2147483648) :
    ∃ s1, Savings.clarke_and_wright I nb s lnum lden neighbors_num fuel = some s1 ∧
      s1.get_cost ≤ 2 * ∑ m in Finset.range (I.vertices_num - 1), I.cost 0 ((m : Int) + 1) := by
  obtain ⟨s1, B, e1, -, c1⟩ := Savings.clarke_and_wright_ok hsym hN hnb hdem hR hmax hc hf hf2
    lnum lden neighbors_num hlim hfit
  refine ⟨s1, e1, ?_⟩
  rw [← singles_cost_eq]
  exact c1 htri

theorem clarke_and_wright_cost_bound_witness :
    (0 : Int) ≤ 2 ∧ Savings.savings_num lineInstance 2 < 2147483648 ∧
    ∃ s1, Savings.clarke_and_wright lineInstance lineNb lineEmpty 1 1 2 5 = some s1 ∧
      s1.get_cost ≤ 2 * ∑ m in Finset.range (lineInstance.vertices_num - 1),
        lineInstance.cost 0 ((m : Int) + 1) :=
  ⟨by decide, by decide,
    clarke_and_wright_cost_bound lineInstance lineInstance_sym (by decide) lineNb lineNb_range
      (fun c c0 c1 => (lineInstance_demand c c0 c1).2) lineInstance_triangle lineEmpty
      (fun _ => []) lineEmpty_rep (by decide) [] lineEmpty_cache 5 (by decide) (by decide) 1 1 2
      (by decide) (by decide)⟩

theorem lineSplit_mutated : Mutated lineInstance 5 lineSplit lineSplitA :=
  Mutated.insert false 2 0 3 [2]
    (Mutated.build false 2 lineOne_mutated (by decide) (by decide) (by decide) (by decide))
    (by decide) (by decide) (by decide) (by decide) (by decide)

theorem lineSplit_complete : ∀ c : Int, 0 < c → c < (lineInstance.vertices_num : Int) →
    ∃ r, c ∈ lineSplitA r := by
  intro c h0 h1
  have h2 : c < 4 := h1
  interval_cases c
  · exact ⟨1, by decide⟩
  · exact ⟨2, by decide⟩
  · exact ⟨2, by decide⟩

theorem lineNb_tail : ∀ c : Int, c ∉ (lineNb c).tail := by
  intro c
  unfold lineNb
  split_ifs with h1 h2 h3
  · subst h1; decide
  · subst h2; decide
  · subst h3; decide
  · simp only [List.tail_cons, List.mem_cons, List.mem_singleton, List.not_mem_nil, or_false,
      not_or]
    exact ⟨h3, h2, h1⟩

/-- C23, counterexample: in `zeroInstance` every demand is 0, at most the capacity 10. The
solution `zeroFull` has the single route 1, which serves the customers 1, 2 and 3. `apply`
with the seed 1 and `omega[1] = 1` removes customer 1; the stored load of route 1 being 0,
the route is taken for empty and removed with the customers 2 and 3 in it; customer 1 gets
a new route. In the end the solution has the single route 1, which serves customer 1 only:
the customers 2 and 3 are served by no route. -/
theorem ruin_and_recreate_zero_demand :
    (∀ c, zeroInstance.demand c ≤ zeroInstance.vehicle_capacity) ∧
    (zeroFull.get_first_route, zeroFull.get_next_route 1, zeroFull.route_customers 1 10,
      zeroFull.get_route_load 1) = (1, 0, some [1, 2, 3], 0) ∧
    (RuinAndRecreate.apply zeroInstance soloNb (fun _ => false) (fun _ => false) 0 id 10
        zeroFull SparseIntSet.create (fun _ => 1) 1).map
      (fun out => (out.2.2.1, out.2.1.get_first_route, out.2.1.get_next_route 1,
        out.2.1.route_customers 1 10)) = some ([1], 1, 0, some [1]) := by
  refine ⟨fun c => ?_, by decide, by decide⟩
  show (0 : Int) ≤ 10
  omega

/-- C23, amended: let the solution be reached by the mutating operations and described by
the cycles `A`, every route with its depot and at least one customer and a load of at most
the vehicle capacity, every customer served, every customer demand positive and at most
the capacity, the cost symmetric, and no customer among its own neighbours. Then, for every
outcome of the random choices (seed customer, coins, ordering of the removed customers),
`apply` returns; the customers it removed are distinct and at most `omega[seed]`; the new
solution is consistent, every customer is again in exactly one route, every route load (of
the cycle, and stored in the route node) is at most the capacity; and each removed
customer, in the solution in which its turn comes, is placed in a new single-customer route
exactly when there is no capacity-admissible candidate position or twice its cost to the
depot is below the least insertion cost, and else at a candidate position of least
insertion cost. -/
theorem ruin_and_recreate_feasible (I : Instance) (nb : Int → List Int)
    (coin1 coin2 : Nat → Bool) (strategy : Nat) (shuffle : List Int → List Int) (fuel : Nat)
    (s : Solution) (A : Nat → List Int) (routes : SparseIntSet) (omega : Int → Int) (seed : Int)
    (hsym : CostSym I) (hf : I.vertices_num < fuel) (hM : Mutated I fuel s A)
    (hdep : ∀ r, A r ≠ [] → (0 : Int) ∈ A r) (hfull : ∀ r, A r ≠ [] → ∃ c ∈ A r, c ≠ 0)
    (hcap : ∀ r, loadOf I (A r) ≤ I.vehicle_capacity)
    (hcomplete : ∀ c : Int, 0 < c → c < (I.vertices_num : Int) → ∃ r, c ∈ A r)
    (hdem : ∀ c : Int, 0 < c → c < (I.vertices_num : Int) →
      0 < I.demand c ∧ I.demand c ≤ I.vehicle_capacity)
    (hnb : ∀ c, c ∉ (nb c).tail) (hok : routes.OK) (hseed0 : 0 < seed)
    (hseedN : seed < (I.vertices_num : Int)) (hsh : ∀ l, (shuffle l).Perm l) :
    ∃ out B,
      RuinAndRecreate.apply I nb coin1 coin2 strategy shuffle fuel s routes omega seed =
        some out ∧
      out.1 = seed ∧ Rep I out.2.1 B ∧ (∀ r, B r ≠ [] → (0 : Int) ∈ B r) ∧
      out.2.2.1.Nodup ∧ out.2.2.1.length ≤ (omega seed).toNat ∧
      (∀ c : Int, 0 < c → c < (I.vertices_num : Int) →
        ∃ r, c ∈ B r ∧ ∀ r2, c ∈ B r2 → r2 = r) ∧
      (∀ r, loadOf I (B r) ≤ I.vehicle_capacity) ∧
      (∀ r, out.2.1.is_route_in_solution r = true →
        out.2.1.get_route_load r ≤ I.vehicle_capacity) ∧
      (∀ pre c post, out.2.2.1 = pre ++ c :: post →
        ∃ sp, RuinAndRecreate.recreate I nb fuel pre
            (RuinAndRecreate.ruin I nb coin1 coin2 (omega seed).toNat 0 s [] routes.clear seed).1
            (RuinAndRecreate.ruin I nb coin1 coin2 (omega seed).toNat 0 s [] routes.clear
              seed).2.2 = some sp ∧
          RuinAndRecreate.Placed I nb fuel sp.1 sp.2 c) := by
  have F : RuinAndRecreate.Sound I fuel s A := ⟨hM, hdep, hfull, hcap⟩
  obtain ⟨hR, _⟩ := hM.inv hsym hf
  obtain ⟨_, _, hclear⟩ := SparseIntSet.clear_spec hok
  obtain ⟨B1, F1, r2, r3, r4, r5, r6, _, r8⟩ := RuinAndRecreate.ruin_sound hsym hf
    (fun c h0 h1 => (hdem c h0 h1).1) nb hnb coin1 coin2 (omega seed).toNat 0 s A [] routes.clear
    seed F (by omega) (hcomplete seed hseed0 hseedN) List.nodup_nil
    (fun v hv => by cases hv) hclear
  generalize hru : RuinAndRecreate.ruin I nb coin1 coin2 (omega seed).toNat 0 s []
    routes.clear seed = ru at F1 r2 r3 r4 r5 r6 r8 ⊢
  have hperm := RuinAndRecreate.arrange_perm I strategy shuffle hsh ru.2.1
  have hrange : ∀ v ∈ RuinAndRecreate.arrange I strategy shuffle ru.2.1,
      0 < v ∧ v < (I.vertices_num : Int) ∧ ∀ r, v ∉ B1 r := by
    intro v hv
    have hv2 : v ∈ ru.2.1 := hperm.mem_iff.1 hv
    obtain ⟨a1, a2⟩ := r4 v hv2
    rcases r6 v hv2 with g | ⟨r, g⟩
    · cases g
    · obtain ⟨b1, b2⟩ := (hR.routes r).range v g
      exact ⟨by omega, b2, a2⟩
  obtain ⟨out, B, o1, o2, o3, o4, o5, o6⟩ := RuinAndRecreate.recreate_sound hsym hf
    (fun c h0 h1 => (hdem c h0 h1).2) nb (RuinAndRecreate.arrange I strategy shuffle ru.2.1)
    ru.1 B1 ru.2.2 F1 r8 (hperm.nodup_iff.2 r2) hrange
  obtain ⟨hRB, _⟩ := o2.mutated.inv hsym hf
  have happly : RuinAndRecreate.apply I nb coin1 coin2 strategy shuffle fuel s routes omega
      seed = some (seed, out.1, RuinAndRecreate.arrange I strategy shuffle ru.2.1, out.2) := by
    unfold RuinAndRecreate.apply
    simp only [hru, o1]
  refine ⟨_, B, happly, rfl, hRB, o2.depot, hperm.nodup_iff.2 r2, ?_, fun c h0 h1 => ?_,
    o2.cap, fun r hr => ?_, o6⟩
  · show (RuinAndRecreate.arrange I strategy shuffle ru.2.1).length ≤ (omega seed).toNat
    rw [hperm.length_eq]
    simpa using r3
  · have hc0 : c ≠ 0 := by omega
    have hex : ∃ r, c ∈ B r := by
      by_cases hin : c ∈ RuinAndRecreate.arrange I strategy shuffle ru.2.1
      · exact o4 c hin
      · obtain ⟨r, hr⟩ := hcomplete c h0 h1
        have hin2 : c ∉ ru.2.1 := fun g => hin (hperm.mem_iff.2 g)
        exact ⟨r, (o5 c hc0 hin r).2 ((r5 c hc0 hin2 r).2 hr)⟩
    obtain ⟨r, hr⟩ := hex
    exact ⟨r, hr, fun r2 h2 => ((hRB.route_of_mem hc0 h2).1).symm.trans (hRB.route_of_mem hc0 hr).1⟩
  · have hB : B r ≠ [] := (hRB.routes r).present_iff.2 hr
    have := (hRB.routes r).load hB
    show (out.1.routes_list r).load ≤ _
    rw [this]
    exact o2.cap r

theorem ruin_and_recreate_feasible_witness :
    ∃ out B,
      RuinAndRecreate.apply lineInstance lineNb (fun _ => true) (fun _ => true) 1 id 5
        lineSplit SparseIntSet.create (fun _ => 2) 3 = some out ∧
      out.1 = 3 ∧ Rep lineInstance out.2.1 B ∧ (∀ r, B r ≠ [] → (0 : Int) ∈ B r) ∧
      out.2.2.1.Nodup ∧ out.2.2.1.length ≤ ((fun _ => 2 : Int → Int) 3).toNat ∧
      (∀ c : Int, 0 < c → c < (lineInstance.vertices_num : Int) →
        ∃ r, c ∈ B r ∧ ∀ r2, c ∈ B r2 → r2 = r) ∧
      (∀ r, loadOf lineInstance (B r) ≤ lineInstance.vehicle_capacity) ∧
      (∀ r, out.2.1.is_route_in_solution r = true →
        out.2.1.get_route_load r ≤ lineInstance.vehicle_capacity) ∧
      (∀ pre c post, out.2.2.1 = pre ++ c :: post →
        ∃ sp, RuinAndRecreate.recreate lineInstance lineNb 5 pre
            (RuinAndRecreate.ruin lineInstance lineNb (fun _ => true) (fun _ => true)
              ((fun _ => 2 : Int → Int) 3).toNat 0 lineSplit [] SparseIntSet.create.clear 3).1
            (RuinAndRecreate.ruin lineInstance lineNb (fun _ => true) (fun _ => true)
              ((fun _ => 2 : Int → Int) 3).toNat 0 lineSplit [] SparseIntSet.create.clear
              3).2.2 = some sp ∧
          RuinAndRecreate.Placed lineInstance lineNb 5 sp.1 sp.2 c) :=
  ruin_and_recreate_feasible lineInstance lineNb (fun _ => true) (fun _ => true) 1 id 5
    lineSplit lineSplitA SparseIntSet.create (fun _ => 2) 3 lineInstance_sym (by decide)
    lineSplit_mutated lineSplit_depot lineSplit_full lineSplit_cap lineSplit_complete
    (fun c h0 h1 => by
      have h2 : c < 4 := h1
      have e : c ≠ 0 := by omega
      show 0 < (if c = 0 then 0 else 2) ∧ (if c = 0 then (0 : Int) else 2) ≤ 10
      rw [if_neg e]
      omega)
    lineNb_tail SparseIntSet.create_ok (by decide) (by decide) (fun l => List.Perm.refl l)

/-! ## Claim C22: the ejection chain -/

theorem pairHeap_exact : ∀ m,
    ((EjectionChain.create pairHeap).moves_heap.heap_index m ≠ -1 ∨
      (EjectionChain.create pairHeap).computed m = true) →
    (EjectionChain.create pairHeap).moves_heap.delta m =
      EjectionChain.compute_cost lineInstance pairMG lineSplit m := by
  intro m h
  by_cases hm : m = 0
  · subst hm
    decide
  · rcases h with h | h
    · exact absurd (show (if m = 0 then (0 : Int) else -1) = -1 by rw [if_neg hm]) h
    · exact absurd h Bool.false_ne_true

/-- C22 (amended): for every complete capacity-feasible solution (represented by the cyclic
lists `A`, every route through the depot, every customer served, no load beyond the
capacity) and every heaped generating move whose stored delta is exact and below
-tolerance and whose first vertex has a non-negative demand, `EjectionChain::is_feasible`
returns (with enough fuel for its loops), and if it returns true then the recorded chain
uses at most 25 relocation nodes and relocates no customer twice, and
`EjectionChain::execute`, applying the chain back to front, leaves every route load at most
the vehicle capacity and changes the total cost by exactly the sum of the single-relocation
deltas evaluated on the solution before the chain, which is at most -tolerance. The other
hypotheses are those of the code: vertex indices fit an `int`, the move generators join
distinct vertices of the instance and store the arc cost, the active list of a customer
holds moves that start at it, the state of the operator is that left by the constructor or
by an earlier call, every stored delta that the search trusts (move in the heap or flagged
as computed) is exact, and the second vertex of the generating move is not the successor
of the first (the assertions of the method). -/
theorem ejection_chain_feasible {I : Instance} {mg : MoveGenerators} {tolerance : Int}
    {s : Solution} {A : Nat → List Int} (hR : Rep I s A)
    (hdep : ∀ r, A r ≠ [] → (0 : Int) ∈ A r)
    (hcomplete : ∀ c : Int, 0 < c → c < (I.vertices_num : Int) → ∃ r, c ∈ A r)
    (hcap : ∀ r, loadOf I (A r) ≤ I.vehicle_capacity)
    (hN : (I.vertices_num : Int) ≤ 2147483647)
    (hmoves : ∀ m, m < mg.moves.length →
      (0 ≤ (mg.get m).1 ∧ (mg.get m).1 < (I.vertices_num : Int)) ∧
      (0 ≤ (mg.get m).2 ∧ (mg.get m).2 < (I.vertices_num : Int)) ∧
      (mg.get m).1 ≠ (mg.get m).2 ∧ mg.get_edge_cost m = I.cost (mg.get m).1 (mg.get m).2)
    (hact : ∀ v : Int, 0 < v → v < (I.vertices_num : Int) →
      ∀ m ∈ mg.get_move_generator_indices_involving_1st v,
        m < mg.moves.length ∧ (mg.get m).1 = v)
    {st : EjectionChain} (hready : st.Ready)
    (hexact : ∀ m, (st.moves_heap.heap_index m ≠ -1 ∨ st.computed m = true) →
      st.moves_heap.delta m = EjectionChain.compute_cost I mg s m)
    {g : Nat} (hg : g < mg.moves.length) (hheaped : st.moves_heap.heap_index g ≠ -1)
    (hlt : st.moves_heap.delta g < -tolerance) (hdem : 0 ≤ I.demand (mg.get g).1)
    (hjn : (mg.get g).2 ≠
      s.get_next_vertex (s.get_route_index_fallback (mg.get g).1 (mg.get g).2) (mg.get g).1)
    {fuel : Nat} (hfuel : I.vertices_num < fuel) (hfuel2 : 25 < fuel) :
    ∃ b st2, EjectionChain.is_feasible I mg tolerance fuel s st g = some (b, st2) ∧
      (b = true →
        st2.recorded.length ≤ 25 ∧ (st2.recorded.map (fun m => (mg.get m).1)).Nodup ∧
        ∃ s2, EjectionChain.execute I mg st2 fuel s = some s2 ∧
          (∀ r, (s2.routes_list r).in_solution = true →
            (s2.routes_list r).load ≤ I.vehicle_capacity) ∧
          s2.solution_cost =
            s.solution_cost + (st2.recorded.map (EjectionChain.compute_cost I mg s)).sum ∧
          (st2.recorded.map (EjectionChain.compute_cost I mg s)).sum ≤ -tolerance) :=
  EjectionChain.is_feasible_spec (served_of_rep hR hdep hcomplete hcap)
    (ends_of_rep hR hdep hcomplete) hN hmoves hact hready hexact hg hheaped hlt hdem hjn hfuel
    hfuel2

theorem ejection_chain_feasible_witness :
    ∃ b st2, EjectionChain.is_feasible lineInstance pairMG 0 26 lineSplit
        (EjectionChain.create pairHeap) 0 = some (b, st2) ∧
      (b = true →
        st2.recorded.length ≤ 25 ∧ (st2.recorded.map (fun m => (pairMG.get m).1)).Nodup ∧
        ∃ s2, EjectionChain.execute lineInstance pairMG st2 26 lineSplit = some s2 ∧
          (∀ r, (s2.routes_list r).in_solution = true →
            (s2.routes_list r).load ≤ lineInstance.vehicle_capacity) ∧
          s2.solution_cost = lineSplit.solution_cost +
            (st2.recorded.map (EjectionChain.compute_cost lineInstance pairMG lineSplit)).sum ∧
          (st2.recorded.map (EjectionChain.compute_cost lineInstance pairMG lineSplit)).sum
            ≤ -0) :=
  @ejection_chain_feasible lineInstance pairMG 0 lineSplit lineSplitA lineSplit_rep.1
    lineSplit_depot lineSplit_complete lineSplit_cap (by decide) (by decide)
    (fun v _ _ m hm => absurd hm (List.not_mem_nil m)) (EjectionChain.create pairHeap)
    ⟨(MGHeap.empty_ok _).linked, by decide, by decide⟩ pairHeap_exact 0 (by decide) (by decide)
    (by decide) (by decide) (by decide) 26 (by decide) (by decide)

/-- C22 fails as stated in three ways. On the ladder of 25 rungs (tolerance 0, generating
move from customer 2 to customer 3, in the heap with its exact delta -1, every route loaded
with at most the capacity 2) `is_feasible` returns true with a chain of 25 relocation
nodes, not fewer. On `brinkI` (tolerance 1, the generating move in the heap with its exact
delta -2) `is_feasible` returns true and `execute` changes the cost by -1, which is
-tolerance and not below it. On `debtI`, where customer 2 has the demand -1 (tolerance 0,
the generating move in the heap with its exact delta -1, both routes loaded with the
capacity 2), `is_feasible` returns true and `execute` leaves route 1 in the solution with
the load 3. -/
theorem ejection_chain_limits :
    ((EjectionChain.is_feasible ladderI (rungMG ladderI) 0 60 (rungS ladderI 25)
        (rungSt ladderI (-1)) (rungG ladderI)).map
      (fun q => (q.1, q.2.recorded.length)) = some (true, 25) ∧
      EjectionChain.compute_cost ladderI (rungMG ladderI) (rungS ladderI 25) (rungG ladderI) =
        (rungSt ladderI (-1)).moves_heap.delta (rungG ladderI) ∧
      (rungSt ladderI (-1)).moves_heap.heap_index (rungG ladderI) = 0 ∧
      ∀ r, r < 52 → ((rungS ladderI 25).routes_list r).load ≤ ladderI.vehicle_capacity) ∧
    ((EjectionChain.is_feasible brinkI (rungMG brinkI) 1 60 (rungS brinkI 2)
        (rungSt brinkI (-2)) (rungG brinkI)).bind
      (fun q => (EjectionChain.execute brinkI (rungMG brinkI) q.2 60 (rungS brinkI 2)).map
        (fun s2 => (q.1, s2.solution_cost - (rungS brinkI 2).solution_cost))) =
        some (true, -1) ∧
      EjectionChain.compute_cost brinkI (rungMG brinkI) (rungS brinkI 2) (rungG brinkI) =
        (rungSt brinkI (-2)).moves_heap.delta (rungG brinkI) ∧
      (rungSt brinkI (-2)).moves_heap.heap_index (rungG brinkI) = 0 ∧
      ∀ r, r < 6 → ((rungS brinkI 2).routes_list r).load ≤ brinkI.vehicle_capacity) ∧
    ((EjectionChain.is_feasible debtI (rungMG debtI) 0 60 (rungS debtI 1)
        (rungSt debtI (-1)) (rungG debtI)).bind
      (fun q => (EjectionChain.execute debtI (rungMG debtI) q.2 60 (rungS debtI 1)).map
        (fun s2 => (q.1, (s2.routes_list 1).in_solution, (s2.routes_list 1).load))) =
        some (true, true, 3) ∧
      EjectionChain.compute_cost debtI (rungMG debtI) (rungS debtI 1) (rungG debtI) =
        (rungSt debtI (-1)).moves_heap.delta (rungG debtI) ∧
      (rungSt debtI (-1)).moves_heap.heap_index (rungG debtI) = 0 ∧
      debtI.vehicle_capacity = 2 ∧
      ∀ r, r < 4 → ((rungS debtI 1).routes_list r).load ≤ debtI.vehicle_capacity) := by
  refine ⟨⟨?_, ?_, ?_, ?_⟩, ⟨?_, ?_, ?_, ?_⟩, ⟨?_, ?_, ?_, ?_, ?_⟩⟩ <;> decide!
/-! ## Claims C38 and C40 -/

/-- C38: for all circle sectors `s1` and `s2` with start and end in `[0, 65535]`,
`CircleSector::overlap(s1, s2)` is true if and only if some angle `p` in `[0, 65535]` is
enclosed in both sectors, also for sectors that wrap around 0. -/
theorem overlap_iff_common_point (s1 s2 : CircleSector)
    (h1 : 0 ≤ s1.start ∧ s1.start ≤ 65535) (h1e : 0 ≤ s1.end_ ∧ s1.end_ ≤ 65535)
    (h2 : 0 ≤ s2.start ∧ s2.start ≤ 65535) (h2e : 0 ≤ s2.end_ ∧ s2.end_ ≤ 65535) :
    CircleSector.overlap s1 s2 = true ↔
      ∃ p : Int, (0 ≤ p ∧ p ≤ 65535) ∧ s1.isEnclosed p = true ∧ s2.isEnclosed p = true := by
  unfold CircleSector.overlap CircleSector.isEnclosed
  simp only [CircleSector.positive_mod_eq, Bool.or_eq_true, decide_eq_true_eq]
  constructor
  · rintro (h | h)
    · exact ⟨s2.start, h2, h, by omega⟩
    · exact ⟨s1.start, h1, by omega, h⟩
  · rintro ⟨p, ⟨p0, p1⟩, a, b⟩
    omega

theorem overlap_iff_common_point_witness :
    CircleSector.overlap ⟨65000, 100⟩ ⟨50, 200⟩ = true ↔
      ∃ p : Int, (0 ≤ p ∧ p ≤ 65535) ∧ CircleSector.isEnclosed ⟨65000, 100⟩ p = true ∧
        CircleSector.isEnclosed ⟨50, 200⟩ p = true :=
  overlap_iff_common_point ⟨65000, 100⟩ ⟨50, 200⟩ (by decide) (by decide) (by decide)
    (by decide)

/-- C40: the claim fails on the code. The source set holds the value 3 (`insert(3)` on a
new set, size 1). Its copy by the copy constructor contains 3 but has no elements and size
0; a new set assigned from the source contains 3 but has no elements and size 0; and a set
that holds 5, assigned from the source, contains 3 and not 5 while its elements are `[5]`. -/
theorem sparse_copy_loses_elements :
    (SparseIntSet.create.insert 3).size = 1 ∧
    (SparseIntSet.copy (SparseIntSet.create.insert 3)).contains 3 = true ∧
    (SparseIntSet.copy (SparseIntSet.create.insert 3)).get_elements = [] ∧
    (SparseIntSet.copy (SparseIntSet.create.insert 3)).size = 0 ∧
    (SparseIntSet.assign SparseIntSet.create (SparseIntSet.create.insert 3)).contains 3 = true ∧
    (SparseIntSet.assign SparseIntSet.create (SparseIntSet.create.insert 3)).get_elements = [] ∧
    (SparseIntSet.assign SparseIntSet.create (SparseIntSet.create.insert 3)).size = 0 ∧
    (SparseIntSet.assign (SparseIntSet.create.insert 5)
      (SparseIntSet.create.insert 3)).contains 3 = true ∧
    (SparseIntSet.assign (SparseIntSet.create.insert 5)
      (SparseIntSet.create.insert 3)).contains 5 = false ∧
    (SparseIntSet.assign (SparseIntSet.create.insert 5)
      (SparseIntSet.create.insert 3)).get_elements = [5] := by
  decide
/-- C39 (code defect): the claim fails on the code. The parents `1 2 3 4 5` and `5 4 3 2 1`
are permutations of the customers and the positions `start = 3` and `end = 2` are distinct.
The source announces "Copy from start to end", with both positions in the range, but the
copying loop `while (j % nbClients != (end + 1) % nbClients)` tests its guard before the
first copy: with `start = (end + 1) mod n` the guard is false at once, nothing of parent 1
is copied, and `crossoverOX` returns parent 2 unchanged. The result `5 4 3 2 1` differs
from parent 1 on the positions 3, 4, 0, 1 of the cyclic range `start..end`, where the claim
and the comment of the source want `1 2 3 4 5`. With `n = 2`, `start = 1`, `end = 0` the
same happens: the result is parent 2, `2 1`, not parent 1. -/
theorem crossoverOX_wrapped_range :
    Genetic.IsTour 5 (fun i => (i : Int) + 1) ∧ Genetic.IsTour 5 (fun i => 5 - (i : Int)) ∧
    (Genetic.crossoverOX 5 (fun _ => 0) (fun i => (i : Int) + 1) (fun i => 5 - (i : Int))
        3 2 6).map (fun r => (List.range 5).map r) = some [5, 4, 3, 2, 1] ∧
    (List.range 5).map (fun i => ((i : Nat) : Int) + 1) = [1, 2, 3, 4, 5] ∧
    (Genetic.crossoverOX 2 (fun _ => 0) (fun i => (i : Int) + 1) (fun i => 2 - (i : Int))
        1 0 3).map (fun r => (List.range 2).map r) = some [2, 1] := by
  refine ⟨by decide, by decide, by decide, by decide, by decide⟩

/-- Order crossover away from the wrapped range: for parents whose first `n` entries are
permutations of the customers `1 .. n` and positions `start, end < n` with
`start ≠ (end + 1) mod n` (the positions need not be distinct), `crossoverOX` returns with
enough fuel (more than `n` iterations of the copying loop), the result is a permutation of
`1 .. n`, it agrees with parent 1 on the cyclic range `start, start + 1, .., end` (the
positions `(start + t) mod n` for `t ≤ (end + n - start) mod n`, the last of which is
`end`), and the positions that follow `end` cyclically hold the customers that were not
copied, in the order in which they appear in parent 2 from position `end + 1` on. -/
theorem crossoverOX_spec (n : Nat) (p1 p2 res0 : Nat → Int) (h1 : Genetic.IsTour n p1)
    (h2 : Genetic.IsTour n p2) (start end_ : Nat) (hs : start < n) (he : end_ < n)
    (hw : start ≠ (end_ + 1) % n) (fuel : Nat) (hf : n < fuel) :
    ∃ res, Genetic.crossoverOX n res0 p1 p2 start end_ fuel = some res ∧
      Genetic.IsTour n res ∧
      (∀ t, t ≤ (end_ + n - start) % n → res ((start + t) % n) = p1 ((start + t) % n)) ∧
      (start + (end_ + n - start) % n) % n = end_ ∧
      (List.range (n - ((end_ + n - start) % n + 1))).map (fun r => res ((end_ + 1 + r) % n)) =
        ((List.range n).map (fun i => p2 ((end_ + 1 + i) % n))).filter
          (fun v => decide (v ∉ (List.range ((end_ + n - start) % n + 1)).map
            (fun t => p1 ((start + t) % n)))) := by
  have hL : (start ≤ end_ ∧ (end_ + n - start) % n = end_ - start) ∨
      (end_ < start ∧ (end_ + n - start) % n = end_ + n - start) := by
    rcases Nat.lt_or_ge end_ start with h | h
    · exact Or.inr ⟨h, Nat.mod_eq_of_lt (by omega)⟩
    · refine Or.inl ⟨h, ?_⟩
      rw [show end_ + n - start = end_ - start + n by omega, Nat.add_mod_right]
      exact Nat.mod_eq_of_lt (by omega)
  have hc : (end_ + n - start) % n + 1 < n := by
    rcases hL with ⟨h, e⟩ | ⟨h, e⟩
    · rw [e]
      by_contra c
      have h0 : start = 0 := by omega
      have h1 : end_ + 1 = n := by omega
      rw [h1, Nat.mod_self] at hw
      exact hw h0
    · rw [e]
      by_contra c
      have h1 : end_ + 1 = start := by omega
      rw [h1, Nat.mod_eq_of_lt hs] at hw
      exact hw rfl
  have hend : (start + (end_ + n - start) % n) % n = end_ := by
    rcases hL with ⟨h, e⟩ | ⟨h, e⟩
    · rw [e, show start + (end_ - start) = end_ by omega]
      exact Nat.mod_eq_of_lt he
    · rw [e, show start + (end_ + n - start) = end_ + n by omega, Nat.add_mod_right]
      exact Nat.mod_eq_of_lt he
  have hstop : (start + ((end_ + n - start) % n + 1)) % n = (end_ + 1) % n := by
    rw [← Nat.add_assoc, Nat.add_mod, hend, Nat.add_mod end_ 1 n, Nat.mod_eq_of_lt he]
  obtain ⟨res, e, t1, t2, t3⟩ := Genetic.crossoverOX_core n p1 p2 res0 h1 h2 start end_
    ((end_ + n - start) % n + 1) hc hstop fuel hf
  exact ⟨res, e, t1, fun t ht => t2 t (by omega), hend, t3⟩

theorem crossoverOX_spec_witness :
    Genetic.IsTour 5 (fun i => (i : Int) + 1) ∧ Genetic.IsTour 5 (fun i => 5 - (i : Int)) ∧
    (1 : Nat) ≠ (2 + 1) % 5 ∧
    ∃ res, Genetic.crossoverOX 5 (fun _ => 0) (fun i => (i : Int) + 1)
        (fun i => 5 - (i : Int)) 1 2 6 = some res ∧
      Genetic.IsTour 5 res ∧
      (∀ t, t ≤ (2 + 5 - 1) % 5 → res ((1 + t) % 5) = (((1 + t) % 5 : Nat) : Int) + 1) ∧
      (1 + (2 + 5 - 1) % 5) % 5 = 2 ∧
      (List.range (5 - ((2 + 5 - 1) % 5 + 1))).map (fun r => res ((2 + 1 + r) % 5)) =
        ((List.range 5).map (fun i => 5 - (((2 + 1 + i) % 5 : Nat) : Int))).filter
          (fun v => decide (v ∉ (List.range ((2 + 5 - 1) % 5 + 1)).map
            (fun t => (((1 + t) % 5 : Nat) : Int) + 1))) := by
  have h := crossoverOX_spec 5 (fun i => (i : Int) + 1) (fun i => 5 - (i : Int)) (fun _ => 0)
    (by decide) (by decide) 1 2 (by decide) (by decide) (by decide) 6 (by decide)
  exact ⟨by decide, by decide, by decide, h⟩
/-- C33 (code defect): with `tolerance = 1`, a move generator whose delta is computed as
`-1 = -tolerance` is left out of the heap by the initialization (`delta < -tolerance` fails),
but the lambda `heap_insert` of the update phase puts it into the heap, or keeps it there
with the new delta, since its first test is `delta > -tolerance`; for the deltas -2 and 0
the two phases agree. -/
theorem update_keeps_boundary_delta :
    (CommonOperator.init_move 1 idleOperator 0 (-1)).map
        (fun st => (st.heap.size, st.heap.heap_index 0, st.heap.delta 0)) = some (0, -1, -1) ∧
    (CommonOperator.heap_insert 1 idleOperator 0 (-1)).map
        (fun st => (st.heap.size, st.heap.heap 0, st.heap.heap_index 0, st.heap.delta 0)) =
      some (1, 0, 0, -1) ∧
    ((CommonOperator.heap_insert 1 idleOperator 0 (-2)).bind
        (fun st => CommonOperator.heap_insert 1 st 0 (-1))).map
        (fun st => (st.heap.size, st.heap.heap 0, st.heap.heap_index 0, st.heap.delta 0)) =
      some (1, 0, 0, -1) ∧
    (CommonOperator.init_move 1 idleOperator 0 (-2)).map
        (fun st => (st.heap.size, st.heap.heap_index 0)) = some (1, 0) ∧
    (CommonOperator.heap_insert 1 idleOperator 0 (-2)).map
        (fun st => (st.heap.size, st.heap.heap_index 0)) = some (1, 0) ∧
    (CommonOperator.init_move 1 idleOperator 0 0).map
        (fun st => (st.heap.size, st.heap.heap_index 0)) = some (0, -1) ∧
    (CommonOperator.heap_insert 1 idleOperator 0 0).map
        (fun st => (st.heap.size, st.heap.heap_index 0)) = some (0, -1) := by
  refine ⟨by decide, by decide, by decide, by decide, by decide, by decide, by decide⟩
/-- C36 (counterexample): the operators 0 and 1 are applied in this order to a solution of
cost 10. Operator 1 lowers the cost to 8, after which `apply` returns without calling
operator 0 again (the log of the calls is `[0, 1]`), although operator 0 lowers the cost of
the returned solution to 7. The composer with this single tier returns the same solution of
cost 8 without any restart, and one more pass of the tier over the returned solution lowers
its cost to 7. -/
theorem rvnd_returns_improvable :
    (RandomizedVariableNeighborhoodDescent.apply costOperators id [0, 1] tenSolution).map
        (fun r => (r.1.get_cost, r.2.2)) = some (8, [0, 1]) ∧
    ((RandomizedVariableNeighborhoodDescent.apply costOperators id [0, 1] tenSolution).bind
        (fun r => costOperators 0 r.1)).map (fun s => s.get_cost) = some 7 ∧
    (VariableNeighborhoodDescentComposer.sequential_apply 1 [costTier] 5 tenSolution).map
        (fun r => (r.1.get_cost, r.2)) = some (8, 0) ∧
    ((VariableNeighborhoodDescentComposer.sequential_apply 1 [costTier] 5 tenSolution).bind
        (fun r => costTier r.1)).map (fun s => s.get_cost) = some 7 := by
  refine ⟨by decide, by decide, by decide, by decide⟩

/-- C36 (amended): the randomized variable neighbourhood descent applies its operators in
the order that the shuffle gives, a permutation of the operators, each exactly once, whether
or not an operator improves the solution: `apply` does not restart. A restart exists in
`sequential_apply` only: whenever it returns, its last pass through the tiers was not left
by `goto __again__`, which is taken when a tier other than the first one has lowered the
cost by more than the tolerance. -/
theorem rvnd_single_pass (run : Nat → Solution → Option Solution)
    (hrun : ∀ op s, ∃ s2, run op s = some s2) (shuffle : List Nat → List Nat)
    (operators : List Nat) (hperm : (shuffle operators).Perm operators) (solution : Solution)
    (tolerance : ℚ) (tiers : List (Solution → Option Solution)) :
    (∃ s2 log, RandomizedVariableNeighborhoodDescent.apply run shuffle operators solution =
        some (s2, shuffle operators, log) ∧ log = shuffle operators ∧ log.Perm operators) ∧
    (∀ fuel s s2 k,
      VariableNeighborhoodDescentComposer.sequential_apply tolerance tiers fuel s =
        some (s2, k) →
      ∃ s1, VariableNeighborhoodDescentComposer.tiers_loop tolerance 0 tiers s1 =
        some (s2, false)) := by
  constructor
  · obtain ⟨s2, e⟩ := RandomizedVariableNeighborhoodDescent.apply_loop_log run hrun
      (shuffle operators) solution []
    refine ⟨s2, shuffle operators, ?_, rfl, hperm⟩
    unfold RandomizedVariableNeighborhoodDescent.apply
    simp only [e, Option.map_some', List.nil_append]
  · intro fuel s s2 k e
    exact VariableNeighborhoodDescentComposer.sequential_apply_last tolerance tiers fuel s s2 k e

theorem rvnd_single_pass_witness :
    (∀ op s, ∃ s2, costOperators op s = some s2) ∧
    (List.reverse [0, 1]).Perm [0, 1] ∧
    (∃ s2 log, RandomizedVariableNeighborhoodDescent.apply costOperators List.reverse [0, 1]
        tenSolution = some (s2, List.reverse [0, 1], log) ∧ log = List.reverse [0, 1] ∧
        log.Perm [0, 1]) ∧
    (∀ fuel s s2 k,
      VariableNeighborhoodDescentComposer.sequential_apply 1 [costTier] fuel s = some (s2, k) →
      ∃ s1, VariableNeighborhoodDescentComposer.tiers_loop 1 0 [costTier] s1 =
        some (s2, false)) :=
  ⟨costOperators_return, by decide,
    rvnd_single_pass costOperators costOperators_return List.reverse [0, 1] (by decide)
      tenSolution 1 [costTier]⟩

/-- C37: with a tolerance above 0 and tiers each of which returns and does not raise the
cost on the solutions of a class `P` that the tiers do not leave and in which no cost is
negative, `sequential_apply` returns on every solution of `P`, with every amount of fuel
(passes through the tiers) that exceeds `cost / tolerance`; the number of restarts is at
most `cost(initial solution) / tolerance`, since each restart has lowered the cost by more
than the tolerance, and the cost has not been raised. -/
theorem sequential_apply_terminates (tolerance : ℚ) (htol : 0 < tolerance)
    (P : Solution → Prop) (tiers : List (Solution → Option Solution))
    (h : ∀ tier ∈ tiers, ∀ s, P s → ∃ s2, tier s = some s2 ∧ P s2 ∧ s2.get_cost ≤ s.get_cost)
    (hnn : ∀ s, P s → 0 ≤ s.get_cost) (s : Solution) (hP : P s) (fuel : Nat)
    (hfuel : (s.get_cost : ℚ) / tolerance < (fuel : ℚ)) :
    ∃ s2 k, VariableNeighborhoodDescentComposer.sequential_apply tolerance tiers fuel s =
        some (s2, k) ∧
      (k : ℚ) ≤ (s.get_cost : ℚ) / tolerance ∧ s2.get_cost ≤ s.get_cost ∧
      (k : ℚ) * tolerance ≤ (s.get_cost : ℚ) - (s2.get_cost : ℚ) := by
  obtain ⟨s2, k, e, P2, c2, hk, -⟩ :=
    VariableNeighborhoodDescentComposer.sequential_apply_spec tolerance htol P tiers h hnn fuel s
      hP ((div_lt_iff₀ htol).1 hfuel)
  refine ⟨s2, k, e, ?_, c2, hk⟩
  rw [le_div_iff₀ htol]
  have : (0 : ℚ) ≤ (s2.get_cost : ℚ) := by exact_mod_cast hnn s2 P2
  linarith

theorem sequential_apply_terminates_witness :
    (0 : ℚ) < 1 ∧
    (∀ tier ∈ [costOperator 10 8, costOperator 8 3], ∀ s, 0 ≤ s.get_cost →
      ∃ s2, tier s = some s2 ∧ 0 ≤ s2.get_cost ∧ s2.get_cost ≤ s.get_cost) ∧
    0 ≤ tenSolution.get_cost ∧ (tenSolution.get_cost : ℚ) / 1 < ((11 : Nat) : ℚ) ∧
    ∃ s2 k, VariableNeighborhoodDescentComposer.sequential_apply 1
        [costOperator 10 8, costOperator 8 3] 11 tenSolution = some (s2, k) ∧
      (k : ℚ) ≤ (tenSolution.get_cost : ℚ) / 1 ∧ s2.get_cost ≤ tenSolution.get_cost ∧
      (k : ℚ) * 1 ≤ (tenSolution.get_cost : ℚ) - (s2.get_cost : ℚ) := by
  have hc : tenSolution.get_cost = 10 := by decide
  have ht : ∀ tier ∈ [costOperator 10 8, costOperator 8 3], ∀ s, 0 ≤ s.get_cost →
      ∃ s2, tier s = some s2 ∧ 0 ≤ s2.get_cost ∧ s2.get_cost ≤ s.get_cost := by
    intro tier ht s hs
    simp only [List.mem_cons, List.mem_singleton, List.not_mem_nil, or_false] at ht
    rcases ht with rfl | rfl
    · exact costOperator_spec 10 8 (by decide) (by decide) s hs
    · exact costOperator_spec 8 3 (by decide) (by decide) s hs
  have hf : (tenSolution.get_cost : ℚ) / 1 < ((11 : Nat) : ℚ) := by
    rw [hc]
    norm_num
  exact ⟨by norm_num, ht, by rw [hc]; decide, hf,
    sequential_apply_terminates 1 (by norm_num) (fun s => 0 ≤ s.get_cost)
      [costOperator 10 8, costOperator 8 3] ht (fun _ hs => hs) tenSolution
      (by show 0 ≤ tenSolution.get_cost; rw [hc]; decide) 11 hf⟩
/-- C34: an initialization phase started on a reset heap (every move generator unheaped),
with empty logs and no vertex timestamp above the value of the timestamp generator, returns,
for every operator, every content `svc` of the SVC, every registry with the properties
`Lists` (which every activation state has) and both values of `handle_partial_solutions`;
in `symmetric_init` as in `asymmetric_init` no move generator occurs twice in the log of the
moves evaluated nor in the log of the moves inserted into the heap, and every move inserted
was evaluated. -/
theorem init_evaluates_once {K12 K1 K2 : Type} (T : AbstractOperator K12 K1 K2)
    (mg : MoveGenerators) (hL : mg.Lists) (tolerance : Int) (handle_partial_solutions : Bool)
    (s : Solution) (svc : List Int) (hsvc : s.cache.Holds svc) (fuel : Nat)
    (hfuel : svc.length < fuel) (st : CommonOperator) (hheap : st.heap.OK)
    (hempty : ∀ m, st.heap.heap_index m = -1)
    (hts : ∀ v, st.vertex_timestamp v ≤ st.timegen)
    (hev : st.evaluated = []) (hins : st.inserted = []) :
    (∃ st2, CommonOperator.symmetric_init T mg tolerance handle_partial_solutions s fuel st =
        some st2 ∧ st2.evaluated.Nodup ∧ st2.inserted.Nodup ∧
        ∀ m ∈ st2.inserted, m ∈ st2.evaluated) ∧
    (∃ st2, CommonOperator.asymmetric_init T mg tolerance handle_partial_solutions s fuel st =
        some st2 ∧ st2.evaluated.Nodup ∧ st2.inserted.Nodup ∧
        ∀ m ∈ st2.inserted, m ∈ st2.evaluated) := by
  constructor
  · obtain ⟨st2, e, hI, -⟩ := CommonOperator.symmetric_init_ok T hL tolerance
      handle_partial_solutions s
      (show CommonOperator.BaseExact T mg s (fun _ _ => True) from
        ⟨fun _ _ _ _ => trivial, fun _ _ => trivial⟩)
      svc hsvc fuel hfuel st hheap hempty hts hev hins
    exact ⟨st2, e, hI.ev_nodup, hI.ins_nodup, hI.ins_sub⟩
  · obtain ⟨st2, e, hI, -⟩ := CommonOperator.asymmetric_init_ok T hL tolerance
      handle_partial_solutions s
      (show CommonOperator.PairExact T mg s (fun _ _ => True) from
        ⟨fun _ _ _ _ => ⟨trivial, trivial⟩, fun _ _ => ⟨trivial, trivial⟩⟩)
      svc hsvc fuel hfuel st hheap hempty hts hev hins
    exact ⟨st2, e, hI.ev_nodup, hI.ins_nodup, hI.ins_sub⟩

theorem init_evaluates_once_witness :
    pairActive.Lists ∧ lineOne.cache.Holds [1] ∧ [(1 : Int)].length < 2 ∧
    idleOperator.heap.OK ∧ (∀ m, idleOperator.heap.heap_index m = -1) ∧
    (∀ v, idleOperator.vertex_timestamp v ≤ idleOperator.timegen) ∧
    idleOperator.evaluated = [] ∧ idleOperator.inserted = [] ∧
    (∃ st2, CommonOperator.symmetric_init (OneOneExchange.operator lineInstance pairActive)
        pairActive 0 false lineOne 2 idleOperator = some st2 ∧ st2.evaluated.Nodup ∧
        st2.inserted.Nodup ∧ ∀ m ∈ st2.inserted, m ∈ st2.evaluated) ∧
    (∃ st2, CommonOperator.asymmetric_init (OneOneExchange.operator lineInstance pairActive)
        pairActive 0 false lineOne 2 idleOperator = some st2 ∧ st2.evaluated.Nodup ∧
        st2.inserted.Nodup ∧ ∀ m ∈ st2.inserted, m ∈ st2.evaluated) :=
  ⟨pairActive_lists, lineOne_cache.1, by decide, MGHeap.empty_ok _, fun _ => rfl,
    fun _ => Nat.le_refl _, rfl, rfl,
    init_evaluates_once (OneOneExchange.operator lineInstance pairActive) pairActive
      pairActive_lists 0 false lineOne [1] lineOne_cache.1 2 (by decide) idleOperator
      (MGHeap.empty_ok _) (fun _ => rfl) (fun _ => Nat.le_refl _) rfl rfl⟩
/-- C32: on a consistent solution in which route `iRoute` is the depot, the customers `P`,
the customer `i` and the customers `X`, and another route `jRoute` is the depot, the
customers `Q`, the customer `j` and the customers `Y`, `swap_tails(i, iRoute, j, jRoute)`
returns with enough fuel (more passes than either tail has customers) a consistent
solution in which `iRoute` is the depot, `P`, `i`, `j`, `Y` (its old part up to `i`, then
the old part of `jRoute` from `j` on), `jRoute` is the depot, `Q`, `X` (its old part before
`j`, then the old part of `iRoute` after `i`), and the other routes are as before; the
total cost has changed by
`cost(i, j) + cost(prev(j), next(i)) - cost(i, next(i)) - cost(prev(j), j)`. -/
theorem swap_tails_spec {I : Instance} {s : Solution} {A : Nat → List Int} (hR : Rep I s A)
    (iRoute jRoute : Nat) (hne : iRoute ≠ jRoute) (i j : Int) (P X Q Y : List Int)
    (hAi : A iRoute ~r (0 :: P ++ i :: X)) (hAj : A jRoute ~r (0 :: Q ++ j :: Y))
    (fuel : Nat) (hf1 : Y.length + 1 < fuel) (hf2 : X.length < fuel) :
    ∃ s2, Solution.swap_tails I s i iRoute j jRoute fuel = some s2 ∧
      Rep I s2 (upd (upd A iRoute (0 :: P ++ i :: j :: Y)) jRoute (0 :: Q ++ X)) ∧
      s2.get_cost = s.get_cost +
        (I.cost i j + I.cost (s.get_prev_vertex jRoute j) (s.get_next_vertex iRoute i) -
          I.cost i (s.get_next_vertex iRoute i) - I.cost (s.get_prev_vertex jRoute j) j) :=
  swap_tails_ok hR hne hAi hAj fuel hf1 hf2

theorem swap_tails_spec_witness :
    Rep lineInstance lineSplit lineSplitA ∧ (1 : Nat) ≠ 2 ∧
    lineSplitA 1 ~r (0 :: [] ++ 1 :: []) ∧ lineSplitA 2 ~r (0 :: [2] ++ 3 :: []) ∧
    ([] : List Int).length + 1 < 3 ∧ ([] : List Int).length < 3 ∧
    ∃ s2, Solution.swap_tails lineInstance lineSplit 1 1 3 2 3 = some s2 ∧
      Rep lineInstance s2 (upd (upd lineSplitA 1 (0 :: [] ++ 1 :: 3 :: [])) 2 (0 :: [2] ++ [])) ∧
      s2.get_cost = lineSplit.get_cost +
        (lineInstance.cost 1 3 +
          lineInstance.cost (lineSplit.get_prev_vertex 2 3) (lineSplit.get_next_vertex 1 1) -
          lineInstance.cost 1 (lineSplit.get_next_vertex 1 1) -
          lineInstance.cost (lineSplit.get_prev_vertex 2 3) 3) :=
  ⟨lineSplit_rep.1, by decide, by decide, by decide, by decide, by decide,
    swap_tails_spec lineSplit_rep.1 1 2 (by decide) 1 3 [] [] [2] [] (by decide) (by decide) 3
      (by decide) (by decide)⟩
/-! ## The moves whose delta a OneOneExchange move leaves unchanged -/

theorem CycNext.mem_left {l : List Int} {x y : Int} (h : CycNext l x y) : x ∈ l := by
  obtain ⟨t, ht⟩ := h
  exact ht.mem_iff.2 (List.mem_cons_self _ _)

theorem CycNext.mem_right {l : List Int} {x y : Int} (h : CycNext l x y) : y ∈ l := by
  obtain ⟨t, ht⟩ := h
  exact ht.mem_iff.2 (List.mem_cons_of_mem _ (List.mem_cons_self _ _))

theorem CycNext.map_next {l : List Int} {x y : Int} (f : Int → Int) (h : CycNext l x y) :
    CycNext (l.map f) (f x) (f y) := by
  obtain ⟨t, ht⟩ := h
  exact ⟨t.map f, by simpa using ht.map f⟩

theorem CycNext.of_rotated {l l2 : List Int} {x y : Int} (hr : l2 ~r l) (h : CycNext l x y) :
    CycNext l2 x y := by
  obtain ⟨t, ht⟩ := h
  exact ⟨t, hr.trans ht⟩

theorem CycNext.exists_next {l : List Int} {x : Int} (hx : x ∈ l) (hlen : 2 ≤ l.length) :
    ∃ y, CycNext l x y := by
  obtain ⟨t, ht⟩ := exists_rotated_cons hx
  have hl := ht.perm.length_eq
  cases t with
  | nil =>
    rw [List.length_singleton] at hl
    omega
  | cons y t => exact ⟨y, t, ht⟩

theorem CycNext.exists_prev {l : List Int} {x : Int} (hx : x ∈ l) (hlen : 2 ≤ l.length) :
    ∃ w, CycNext l w x := by
  obtain ⟨t, ht⟩ := exists_rotated_cons hx
  have hl := ht.perm.length_eq
  rcases List.eq_nil_or_concat t with e | ⟨t2, w, e⟩
  · rw [e, List.length_singleton] at hl
    omega
  · refine ⟨w, t2, ht.trans ?_⟩
    rw [e]
    have := @List.isRotated_append _ (x :: t2) [w]
    simpa using this

section Local

variable {I : Instance} {s s2 : Solution} {A B : Nat → List Int}

/-- The links and the cached cost at two consecutive vertices of a route. -/
theorem CycNext.route_links {r : Nat} {l : List Int} (h : RouteRep I s r l) {x y : Int}
    (hxy : CycNext l x y) :
    s.get_next_vertex r x = y ∧ s.get_prev_vertex r y = x ∧
    s.get_cost_prev_vertex r y = I.cost x y := by
  obtain ⟨t, ht⟩ := hxy
  obtain ⟨a1, a2, a3, _, _⟩ := h.adjacent ht
  exact ⟨a1, a2, a3⟩

/-- A vertex of a route with two vertices or more is followed by its successor and
preceded by its predecessor. -/
theorem Rep.cyc_links (hR : Rep I s A) {r : Nat} {x : Int} (hx : x ∈ A r)
    (hlen : 2 ≤ (A r).length) :
    CycNext (A r) x (s.get_next_vertex r x) ∧ CycNext (A r) (s.get_prev_vertex r x) x := by
  obtain ⟨y, hy⟩ := CycNext.exists_next hx hlen
  obtain ⟨w, hw⟩ := CycNext.exists_prev hx hlen
  have e1 := (CycNext.route_links (hR.routes r) hy).1
  have e2 := (CycNext.route_links (hR.routes r) hw).2.1
  rw [e1, e2]
  exact ⟨hy, hw⟩

/-- A route with the depot and a customer has two vertices or more. -/
theorem two_le_length {l : List Int} (h0 : (0 : Int) ∈ l) (hc : ∃ c ∈ l, c ≠ 0) :
    2 ≤ l.length := by
  obtain ⟨c, hc, hc0⟩ := hc
  cases l with
  | nil => cases h0
  | cons a t =>
    cases t with
    | nil =>
      rw [List.mem_singleton] at h0 hc
      exact absurd (hc.trans h0.symm) hc0
    | cons b t => simp

/-- The links of the route `r` after a change that maps its cyclic list by `f`. -/
theorem links_after (hR : Rep I s A) (hR2 : Rep I s2 B) {r : Nat} {f : Int → Int}
    (hB : B r ~r (A r).map f) (hlen : 2 ≤ (A r).length) {x : Int} (hx : x ∈ A r) :
    s2.get_next_vertex r (f x) = f (s.get_next_vertex r x) ∧
    s2.get_prev_vertex r (f x) = f (s.get_prev_vertex r x) ∧
    s2.get_cost_prev_vertex r (f x) = I.cost (f (s.get_prev_vertex r x)) (f x) ∧
    f x ∈ B r := by
  obtain ⟨h1, h2⟩ := hR.cyc_links hx hlen
  have k1 := CycNext.of_rotated hB (h1.map_next f)
  have k2 := CycNext.of_rotated hB (h2.map_next f)
  exact ⟨(CycNext.route_links (hR2.routes r) k1).1, (CycNext.route_links (hR2.routes r) k2).2.1,
    (CycNext.route_links (hR2.routes r) k2).2.2, k1.mem_left⟩

/-- The value of `compute_cost` in terms of the neighbours of the endpoints. -/
theorem compute_cost_links (hR : Rep I s A) (hdep : ∀ r, A r ≠ [] → (0 : Int) ∈ A r)
    (hfull : ∀ r, A r ≠ [] → ∃ c ∈ A r, c ≠ 0) {a b : Int} (hab : a ≠ b)
    (ha : a ≠ 0 → (s.customers_list a).route_ptr ≠ 0)
    (hb : b ≠ 0 → (s.customers_list b).route_ptr ≠ 0) :
    OneOneExchange.compute_cost I s a b =
      I.cost (s.get_prev_vertex (s.get_route_index_fallback b a)
          (s.get_prev_vertex (s.get_route_index_fallback b a) b)) a + I.cost a b +
        I.cost (s.get_prev_vertex (s.get_route_index_fallback a b) a)
          (s.get_prev_vertex (s.get_route_index_fallback b a) b) +
        I.cost (s.get_prev_vertex (s.get_route_index_fallback b a) b)
          (s.get_next_vertex (s.get_route_index_fallback a b) a) -
        I.cost (s.get_prev_vertex (s.get_route_index_fallback a b) a) a -
        I.cost a (s.get_next_vertex (s.get_route_index_fallback a b) a) -
        I.cost (s.get_prev_vertex (s.get_route_index_fallback b a)
          (s.get_prev_vertex (s.get_route_index_fallback b a) b))
          (s.get_prev_vertex (s.get_route_index_fallback b a) b) -
        I.cost (s.get_prev_vertex (s.get_route_index_fallback b a) b) b := by
  obtain ⟨haA, hbA⟩ := endpoints_mem hR hdep hab ha hb
  unfold OneOneExchange.compute_cost
  simp only
  generalize s.get_route_index_fallback a b = ra at haA ⊢
  generalize s.get_route_index_fallback b a = rb at hbA ⊢
  have la := two_le_length (hdep ra (List.ne_nil_of_mem haA)) (hfull ra (List.ne_nil_of_mem haA))
  have lb := two_le_length (hdep rb (List.ne_nil_of_mem hbA)) (hfull rb (List.ne_nil_of_mem hbA))
  obtain ⟨a1, a2⟩ := hR.cyc_links haA la
  obtain ⟨b1, b2⟩ := hR.cyc_links hbA lb
  obtain ⟨c1, c2⟩ := hR.cyc_links b2.mem_left lb
  have e1 := (CycNext.route_links (hR.routes ra) a2).2.2
  have e2 := (CycNext.route_links (hR.routes ra) a1).2.2
  have e3 := (CycNext.route_links (hR.routes rb) c2).2.2
  have e4 := (CycNext.route_links (hR.routes rb) b2).2.2
  simp only [e1, e2, e3, e4]
  ring

end Local
section Local2

variable {I : Instance} {s s2 : Solution} {A B : Nat → List Int}

/-- The neighbours of a vertex of a route are vertices of the route, and the links are
inverse to each other. -/
theorem Rep.nbrs (hR : Rep I s A) {r : Nat} {x : Int} (hx : x ∈ A r) :
    s.get_next_vertex r x ∈ A r ∧ s.get_prev_vertex r x ∈ A r ∧
    s.get_prev_vertex r (s.get_next_vertex r x) = x ∧
    s.get_next_vertex r (s.get_prev_vertex r x) = x := by
  have hc := (hR.routes r).cycle (List.ne_nil_of_mem hx)
  obtain ⟨a1, a2, a3, a4, _⟩ := IsCycle_facts hc x hx
  exact ⟨a3, a4, a1, a2⟩

/-- A move `(a, b)` whose first endpoint is none of the vertices that `execute` marks with
the first update bit and whose second endpoint is none of those it marks with the second
one has the same `compute_cost` after the move `(i, j)` as before. -/
theorem compute_cost_local (hR : Rep I s A) (hdep : ∀ r, A r ≠ [] → (0 : Int) ∈ A r)
    (hfull : ∀ r, A r ≠ [] → ∃ c ∈ A r, c ≠ 0) {i j : Int} (hij : i ≠ j)
    (hi : i ≠ 0 → (s.customers_list i).route_ptr ≠ 0)
    (hj : j ≠ 0 → (s.customers_list j).route_ptr ≠ 0)
    (hf : OneOneExchange.is_feasible I s i j = true)
    (hR2 : Rep I s2 B) (hdepB : ∀ r, B r ≠ [] → (0 : Int) ∈ B r)
    (hfullB : ∀ r, B r ≠ [] → ∃ c ∈ B r, c ≠ 0)
    (hB : ∀ r, B r ~r
      (if r = s.get_route_index_fallback i j ∨ r = s.get_route_index_fallback j i then
        (A r).map (fun v =>
          if v = i then s.get_prev_vertex (s.get_route_index_fallback j i) j
          else if v = s.get_prev_vertex (s.get_route_index_fallback j i) j then i else v)
      else A r))
    {a b : Int} (hab : a ≠ b) (ha : a ≠ 0 → (s.customers_list a).route_ptr ≠ 0)
    (hb : b ≠ 0 → (s.customers_list b).route_ptr ≠ 0)
    (haF : a ∉ OneOneExchange.marked_first s i j)
    (hbS : b ∉ OneOneExchange.marked_second s i j) :
    OneOneExchange.compute_cost I s2 a b = OneOneExchange.compute_cost I s a b := by
  have hshape := exchange_shape hR hdep hij hi hj hf
  obtain ⟨hiA, hjA⟩ := endpoints_mem hR hdep hij hi hj
  unfold OneOneExchange.marked_first at haF
  unfold OneOneExchange.marked_second at hbS
  simp only [List.mem_cons, List.mem_singleton, List.not_mem_nil, or_false, not_or] at haF hbS
  obtain ⟨haF1, haF2, haF3, haF4, haF5, haF6⟩ := haF
  obtain ⟨hbS1, hbS2, hbS3, hbS4, hbS5, hbS6⟩ := hbS
  generalize hri : s.get_route_index_fallback i j = ri at *
  generalize hrj : s.get_route_index_fallback j i = rj at *
  have hpA : s.get_prev_vertex rj j ∈ A rj := (hR.nbrs hjA).2.1
  generalize hp : s.get_prev_vertex rj j = p at *
  -- the routes of `i` and of `p` among the two routes of the move
  have home_i : ∀ r, (r = ri ∨ r = rj) → i ∈ A r → r = ri := by
    intro r hr hin
    rcases hshape with ⟨hsame, -⟩ | ⟨-, hi0, -, -⟩
    · rcases hr with e | e
      · exact e
      · exact e.trans hsame.symm
    · exact ((hR.route_of_mem hi0 hin).1).symm.trans (hR.route_of_mem hi0 hiA).1
  have home_p : ∀ r, (r = ri ∨ r = rj) → p ∈ A r → r = rj := by
    intro r hr hin
    rcases hshape with ⟨hsame, -⟩ | ⟨-, -, hp0, -⟩
    · rcases hr with e | e
      · exact e.trans hsame
      · exact e
    · exact ((hR.route_of_mem hp0 hin).1).symm.trans (hR.route_of_mem hp0 hpA).1
  -- the map of a route
  let f : Nat → Int → Int := fun r =>
    if r = ri ∨ r = rj then (fun v => if v = i then p else if v = p then i else v) else id
  have hBf : ∀ r, B r ~r (A r).map (f r) := by
    intro r
    have := hB r
    by_cases c : r = ri ∨ r = rj
    · rw [if_pos c] at this
      show B r ~r (A r).map (if r = ri ∨ r = rj then _ else id)
      rw [if_pos c]
      exact this
    · rw [if_neg c] at this
      show B r ~r (A r).map (if r = ri ∨ r = rj then _ else id)
      rw [if_neg c, List.map_id]
      exact this
  have hfix : ∀ r x, ((r = ri ∨ r = rj) → x ≠ i ∧ x ≠ p) → f r x = x := by
    intro r x h
    show (if r = ri ∨ r = rj then (fun v => if v = i then p else if v = p then i else v)
      else id) x = x
    by_cases c : r = ri ∨ r = rj
    · rw [if_pos c]
      obtain ⟨h1, h2⟩ := h c
      show (if x = i then p else if x = p then i else x) = x
      rw [if_neg h1, if_neg h2]
    · rw [if_neg c]
      rfl
  have hlen : ∀ r x, x ∈ A r → 2 ≤ (A r).length := fun r x hx =>
    two_le_length (hdep r (List.ne_nil_of_mem hx)) (hfull r (List.ne_nil_of_mem hx))
  -- the links of a vertex that is neither `i` nor `p`
  have key : ∀ r x, x ∈ A r → ((r = ri ∨ r = rj) → x ≠ i ∧ x ≠ p) →
      x ∈ B r ∧
      (((r = ri ∨ r = rj) → s.get_next_vertex r x ≠ i ∧ s.get_next_vertex r x ≠ p) →
        s2.get_next_vertex r x = s.get_next_vertex r x) ∧
      (((r = ri ∨ r = rj) → s.get_prev_vertex r x ≠ i ∧ s.get_prev_vertex r x ≠ p) →
        s2.get_prev_vertex r x = s.get_prev_vertex r x) := by
    intro r x hx hxip
    obtain ⟨l1, l2, _, l4⟩ := links_after hR hR2 (hBf r) (hlen r x hx) hx
    rw [hfix r x hxip] at l1 l2 l4
    exact ⟨l4, fun h => by rw [l1]; exact hfix r _ h, fun h => by rw [l2]; exact hfix r _ h⟩
  have fwd : ∀ r x y, x ∈ A r → s.get_next_vertex r x = y → x = s.get_prev_vertex r y :=
    fun r x y hx e => by rw [← e]; exact (hR.nbrs hx).2.2.1.symm
  have back : ∀ r x y, x ∈ A r → s.get_prev_vertex r x = y → x = s.get_next_vertex r y :=
    fun r x y hx e => by rw [← e]; exact (hR.nbrs hx).2.2.2.symm
  have hnj : s.get_next_vertex rj p = j := by
    rw [← hp]
    exact (hR.nbrs hjA).2.2.2
  -- the routes of `a` and `b`
  obtain ⟨haA, hbA⟩ := endpoints_mem hR hdep hab ha hb
  have hptr : ∀ x, x ≠ 0 → (s.customers_list x).route_ptr ≠ 0 → x ≠ i → x ≠ p →
      (s2.customers_list x).route_ptr = (s.customers_list x).route_ptr := by
    intro x hx0 hx hxi hxp
    have hin : x ∈ A (s.customers_list x).route_ptr := ((hR.routes _).mem_iff x hx0).2 ⟨rfl, hx⟩
    exact (hR2.route_of_mem hx0 (key _ x hin (fun _ => ⟨hxi, hxp⟩)).1).1
  have hra : s2.get_route_index_fallback a b = s.get_route_index_fallback a b := by
    unfold Solution.get_route_index_fallback
    by_cases a0 : a = 0
    · rw [if_pos a0, if_pos a0]
      have b0 : b ≠ 0 := fun e => hab (a0.trans e.symm)
      exact hptr b b0 (hb b0) hbS1 hbS4
    · rw [if_neg a0, if_neg a0]
      exact hptr a a0 (ha a0) haF2 haF5
  have hrb : s2.get_route_index_fallback b a = s.get_route_index_fallback b a := by
    unfold Solution.get_route_index_fallback
    by_cases b0 : b = 0
    · rw [if_pos b0, if_pos b0]
      have a0 : a ≠ 0 := fun e => hab (e.trans b0.symm)
      exact hptr a a0 (ha a0) haF2 haF5
    · rw [if_neg b0, if_neg b0]
      exact hptr b b0 (hb b0) hbS1 hbS4
  have ha2 : a ≠ 0 → (s2.customers_list a).route_ptr ≠ 0 := fun a0 => by
    rw [hptr a a0 (ha a0) haF2 haF5]
    exact ha a0
  have hb2 : b ≠ 0 → (s2.customers_list b).route_ptr ≠ 0 := fun b0 => by
    rw [hptr b b0 (hb b0) hbS1 hbS4]
    exact hb b0
  rw [compute_cost_links hR hdep hfull hab ha hb,
    compute_cost_links hR2 hdepB hfullB hab ha2 hb2, hra, hrb]
  generalize s.get_route_index_fallback a b = ra at haA ⊢
  generalize s.get_route_index_fallback b a = rb at hbA ⊢
  obtain ⟨na, pa, -, -⟩ := hR.nbrs haA
  obtain ⟨-, pb, -, -⟩ := hR.nbrs hbA
  obtain ⟨-, ka1, ka2⟩ := key ra a haA (fun _ => ⟨haF2, haF5⟩)
  obtain ⟨-, -, kb2⟩ := key rb b hbA (fun _ => ⟨hbS1, hbS4⟩)
  have e1 : s2.get_next_vertex ra a = s.get_next_vertex ra a := ka1 (fun hr =>
    ⟨fun e => haF1 (by rw [← home_i ra hr (e ▸ na)]; exact fwd ra a i haA e),
     fun e => haF4 (by rw [← home_p ra hr (e ▸ na)]; exact fwd ra a p haA e)⟩)
  have e2 : s2.get_prev_vertex ra a = s.get_prev_vertex ra a := ka2 (fun hr =>
    ⟨fun e => haF3 (by rw [← home_i ra hr (e ▸ pa)]; exact back ra a i haA e),
     fun e => haF6 (by rw [← hnj, ← home_p ra hr (e ▸ pa)]; exact back ra a p haA e)⟩)
  have hq : (rb = ri ∨ rb = rj) → s.get_prev_vertex rb b ≠ i ∧ s.get_prev_vertex rb b ≠ p :=
    fun hr =>
    ⟨fun e => hbS2 (by rw [← home_i rb hr (e ▸ pb)]; exact back rb b i hbA e),
     fun e => hbS5 (by rw [← hnj, ← home_p rb hr (e ▸ pb)]; exact back rb b p hbA e)⟩
  have e3 : s2.get_prev_vertex rb b = s.get_prev_vertex rb b := kb2 hq
  obtain ⟨-, ppb, -, -⟩ := hR.nbrs pb
  obtain ⟨-, -, kc2⟩ := key rb _ pb hq
  have e4 : s2.get_prev_vertex rb (s.get_prev_vertex rb b) =
      s.get_prev_vertex rb (s.get_prev_vertex rb b) := kc2 (fun hr =>
    ⟨fun e => hbS3 (by
        have h1 := back rb _ i pb e
        have h2 := back rb b _ hbA rfl
        rw [← home_i rb hr (e ▸ ppb), ← h1]
        exact h2),
     fun e => hbS6 (by
        have h1 := back rb _ p pb e
        have h2 := back rb b _ hbA rfl
        have hr2 := home_p rb hr (e ▸ ppb)
        rw [← hr2] at hnj ⊢
        rw [hnj] at h1
        rw [← h1]
        exact h2)⟩)
  rw [e1, e2, e3, e4]

end Local2
/-! ## The update phase of the local search -/

namespace MGHeap

/-- A generator with a heap index is at the position of its heap index. -/
theorem Linked.position {st : MGHeap} (h : st.Linked) {m : Nat} (hm : st.heap_index m ≠ -1) :
    (st.heap_index m).toNat < st.size ∧ st.heap (st.heap_index m).toNat = m := by
  by_cases c : ∃ k, k < st.size ∧ st.heap k = m
  · obtain ⟨k, hk, e⟩ := c
    have := h.idx k hk
    rw [e] at this
    rw [this]
    simp only [Int.toNat_ofNat]
    exact ⟨hk, e⟩
  · exact absurd (h.out m (fun k hk e => c ⟨k, hk, e⟩)) hm

end MGHeap

namespace CommonOperator

/-- The lambda `heap_insert` on a consistent heap: it returns, the heap stays consistent,
the delta of the move is the one given, no other move enters the heap, and the move is in
the heap only if its delta is not above `-tolerance`. -/
theorem heap_insert_heap_spec (tolerance : Int) (h : MGHeap) (hok : h.OK) (m : Nat) (d : Int) :
    ∃ h2, heap_insert_heap tolerance h m d = some h2 ∧ h2.OK ∧
      h2.delta = upd h.delta m d ∧
      (∀ x, h2.heap_index x ≠ -1 → x = m ∨ h.heap_index x ≠ -1) ∧
      (h2.heap_index m ≠ -1 → d ≤ -tolerance) := by
  unfold heap_insert_heap
  by_cases c : d > -tolerance
  · rw [if_pos c]
    by_cases c2 : h.heap_index m ≠ -1
    · rw [if_pos c2]
      obtain ⟨hk, hm⟩ := hok.linked.position c2
      obtain ⟨h2, e, r1, _, r3, r4, r5⟩ := MGHeap.remove_ok h _ hok hk
      rw [hm] at r4
      rw [e]
      refine ⟨h2.set_delta m d, rfl, MGHeap.set_delta_ok h2 m d r1 r4, ?_, ?_, ?_⟩
      · show upd h2.delta m d = upd h.delta m d
        rw [r3]
      · intro x hx
        right
        intro hx2
        exact hx (r5 x hx2)
      · intro hx
        exact absurd r4 hx
    · rw [if_neg c2]
      have c3 : h.heap_index m = -1 := not_not.1 c2
      refine ⟨_, rfl, MGHeap.set_delta_ok h m d hok c3, rfl, fun x hx => Or.inr hx, ?_⟩
      intro hx
      exact absurd c3 hx
  · rw [if_neg c]
    have hd : d ≤ -tolerance := not_lt.1 c
    by_cases c2 : h.heap_index m = -1
    · rw [if_pos c2]
      obtain ⟨h2, e, r1, _, r3, _, r5⟩ := MGHeap.insert_ok (h.set_delta m d) m
        (MGHeap.set_delta_ok h m d hok c2) c2
      refine ⟨h2, e, r1, r3, ?_, fun _ => hd⟩
      intro x hx
      by_cases cx : x = m
      · exact Or.inl cx
      · right
        intro hx2
        exact hx (r5 x cx hx2)
    · rw [if_neg c2]
      obtain ⟨hk, hm⟩ := hok.linked.position c2
      obtain ⟨h2, e, r1, _, r3, r5⟩ := MGHeap.change_value_ok h _ d hok hk
      rw [hm] at r3
      refine ⟨h2, e, r1, r3, ?_, fun _ => hd⟩
      intro x hx
      right
      intro hx2
      exact hx (r5 x hx2)

/-- The lambda `heap_insert` called with the delta `V m` of the move `m`: the invariant of
the update is kept, the deltas that were right stay so, and the delta of `m` is right. -/
theorem heap_insert_inv {mg : MoveGenerators} {tolerance : Int} {V : Nat → Int} {ct : Nat}
    {st : CommonOperator} (hU : UpdInv mg tolerance V ct st) (m : Nat) (hm : m < mg.size)
    (hact : m ∈ mg.active_move_indices_involving_1st (mg.get m).1) :
    ∃ st2, heap_insert tolerance st m (V m) = some st2 ∧ UpdInv mg tolerance V ct st2 ∧
      SameFrame st2 st ∧ (∀ x, Correct V st x → Correct V st2 x) ∧ Correct V st2 m := by
  obtain ⟨h2, e, r1, r2, r3, r4⟩ := heap_insert_heap_spec tolerance st.heap hU.heap_ok m (V m)
  unfold heap_insert
  rw [e]
  have hdel : ∀ x, h2.delta x = if x = m then V m else st.heap.delta x := by
    intro x
    rw [r2]
    rfl
  refine ⟨_, rfl, ⟨r1, ?_, ?_, ?_, hU.marked⟩, ⟨rfl, rfl, rfl, rfl⟩, ?_, ?_⟩
  · intro x hx
    rcases r3 x hx with c | c
    · rw [c]
      exact ⟨hm, hact⟩
    · exact hU.act x c
  · intro x hx
    show h2.delta x ≤ -tolerance
    rw [hdel]
    by_cases c : x = m
    · rw [if_pos c]
      exact r4 (c ▸ hx)
    · rw [if_neg c]
      rcases r3 x hx with c2 | c2
      · exact absurd c2 c
      · exact hU.low x c2
  · intro x hx hdone
    show h2.delta x = V x
    rw [hdel]
    by_cases c : x = m
    · rw [if_pos c, c]
    · rw [if_neg c]
      rcases r3 x hx with c2 | c2
      · exact absurd c2 c
      · exact hU.val x c2 hdone
  · intro x hc hx
    show h2.delta x = V x
    rw [hdel]
    by_cases c : x = m
    · rw [if_pos c, c]
    · rw [if_neg c]
      rcases r3 x hx with c2 | c2
      · exact absurd c2 c
      · exact hc c2
  · intro hx
    show h2.delta m = V m
    rw [hdel, if_pos rfl]

end CommonOperator
namespace CommonOperator

/-- A loop whose body keeps an invariant `J`, keeps what has been achieved and achieves `Q`
for the element it visits. -/
theorem fold_progress {σ : Type} {J : σ → Prop} {Q : Nat → σ → Prop}
    {step : σ → Nat → Option σ} {L : List Nat}
    (hstep : ∀ st idx, J st → idx ∈ L →
      ∃ st2, step st idx = some st2 ∧ J st2 ∧ (∀ x, Q x st → Q x st2) ∧ Q idx st2) :
    ∀ (rest : List Nat) (st : σ), J st → (∀ x ∈ rest, x ∈ L) →
      ∃ st2, rest.foldlM step st = some st2 ∧ J st2 ∧ (∀ x, Q x st → Q x st2) ∧
        ∀ x ∈ rest, Q x st2 := by
  intro rest
  induction rest with
  | nil =>
    intro st hI _
    exact ⟨st, rfl, hI, fun _ h => h, fun x hx => absurd hx (List.not_mem_nil x)⟩
  | cons idx rest ih =>
    intro st hI hall
    obtain ⟨st1, e1, I1, m1, p1⟩ := hstep st idx hI (hall idx (List.mem_cons_self _ _))
    obtain ⟨st2, e2, I2, m2, p2⟩ := ih st1 I1 (fun x hx => hall x (List.mem_cons_of_mem _ hx))
    refine ⟨st2, ?_, I2, fun x h => m2 x (m1 x h), fun x hx => ?_⟩
    · rw [List.foldlM_cons, e1]
      exact e2
    · rcases List.mem_cons.1 hx with c | c
      · rw [c]
        exact m2 idx p1
      · exact p2 x c

/-- A move of the view of the active list of `i` through the twins is a move of the active
list of its first vertex. -/
theorem second_view {mg : MoveGenerators} (hL : mg.Lists) {i : Int} {m : Nat}
    (hm : m ∈ mg.get_move_generator_indices_involving_2nd i) :
    m < mg.size ∧ m ∈ mg.active_move_indices_involving_1st (mg.get m).1 ∧
    (mg.get m).2 = i ∧ MoveGenerators.get_twin_move_generator_index m ∈
      mg.active_move_indices_involving_1st i := by
  unfold MoveGenerators.get_move_generator_indices_involving_2nd at hm
  obtain ⟨idx, hin, e⟩ := List.mem_map.1 hm
  obtain ⟨hlt, hfst⟩ := hL.mem i idx hin
  have htw := hL.twin_get idx hlt
  rw [← e, htw, MoveGenerators.twin_twin]
  exact ⟨hL.twin_lt idx hlt, hL.sym i idx hin, hfst, hin⟩

section Steps

variable {K12 K1 K2 : Type} {T : AbstractOperator K12 K1 K2} {mg : MoveGenerators}
  (hL : mg.Lists) {tolerance : Int} {s : Solution} {V : Nat → Int} {ct : Nat}
  (hX : UpdExact T mg s V)
include hL hX

/-- The body of the loop of a customer with both update bits. -/
theorem update_both_step_ok (i : Int) (hi0 : i ≠ 0) (st : CommonOperator) (idx : Nat)
    (hU : UpdInv mg tolerance V ct st) (hin : idx ∈ mg.active_move_indices_involving_1st i) :
    ∃ st2, update_both_step T mg tolerance false s ct i (T.prepare_cache12 s i) st idx =
        some st2 ∧ UpdInv mg tolerance V ct st2 ∧ SameFrame st2 st ∧
      (∀ x, Correct V st x → Correct V st2 x) ∧ Correct V st2 idx ∧
      Correct V st2 (MoveGenerators.get_twin_move_generator_index idx) := by
  obtain ⟨hlt, hfst⟩ := hL.mem i idx hin
  have htw := hL.twin_get idx hlt
  have htlt := hL.twin_lt idx hlt
  have htact : MoveGenerators.get_twin_move_generator_index idx ∈
      mg.active_move_indices_involving_1st
        (mg.get (MoveGenerators.get_twin_move_generator_index idx)).1 := by
    rw [htw]
    exact hL.sym i idx hin
  have hiact : idx ∈ mg.active_move_indices_involving_1st (mg.get idx).1 := by
    rw [hfst]
    exact hin
  unfold update_both_step
  dsimp only
  rw [if_neg (by simp)]
  by_cases c : st.vertex_timestamp (mg.get idx).2 = ct
  · rw [if_pos c]
    cases hF : st.update_bits (mg.get idx).2 UPDATE_BITS_FIRST <;>
      cases hS : st.update_bits (mg.get idx).2 UPDATE_BITS_SECOND
    · rcases hU.marked _ c with h | h
      · rw [hF] at h
        cases h
      · rw [hS] at h
        cases h
    · have hidx : Correct V st idx := fun hx =>
        hU.val idx hx (Or.inr (Or.inr ⟨hS, c⟩))
      rw [if_neg (by simp), if_neg (by simp), if_pos rfl, hX.both_second i idx hi0 hin]
      obtain ⟨st2, e, U2, F2, m2, p2⟩ := heap_insert_inv hU _ htlt htact
      exact ⟨st2, e, U2, F2, m2, m2 idx hidx, p2⟩
    · have htwin : Correct V st (MoveGenerators.get_twin_move_generator_index idx) :=
        fun hx => hU.val _ hx (Or.inr (Or.inl (by rw [htw]; exact ⟨hF, c⟩)))
      rw [if_neg (by simp), if_pos rfl, hX.both_first i idx hi0 hin]
      obtain ⟨st2, e, U2, F2, m2, p2⟩ := heap_insert_inv hU idx hlt hiact
      exact ⟨st2, e, U2, F2, m2, p2, m2 _ htwin⟩
    · rw [if_pos (by simp)]
      refine ⟨st, rfl, hU, SameFrame.frame_refl st, fun _ h => h, ?_, ?_⟩
      · exact fun hx => hU.val idx hx (Or.inr (Or.inr ⟨hS, c⟩))
      · exact fun hx => hU.val _ hx (Or.inr (Or.inl (by rw [htw]; exact ⟨hF, c⟩)))
  · rw [if_neg c, hX.both_pair i idx hi0 hin]
    obtain ⟨st1, e1, U1, F1, m1, p1⟩ := heap_insert_inv hU idx hlt hiact
    obtain ⟨st2, e2, U2, F2, m2, p2⟩ := heap_insert_inv U1 _ htlt htact
    refine ⟨st2, ?_, U2, F2.frame_trans F1, fun x h => m2 x (m1 x h), m2 idx p1, p2⟩
    dsimp only
    rw [e1]
    exact e2

/-- The body of the loop of a customer with the first update bit only. -/
theorem update_first_step_ok (i : Int) (hi0 : i ≠ 0) (st : CommonOperator) (idx : Nat)
    (hU : UpdInv mg tolerance V ct st) (hin : idx ∈ mg.active_move_indices_involving_1st i) :
    ∃ st2, update_first_step T mg tolerance false s ct i (T.prepare_cache1 s i) st idx =
        some st2 ∧ UpdInv mg tolerance V ct st2 ∧ SameFrame st2 st ∧
      (∀ x, Correct V st x → Correct V st2 x) ∧ Correct V st2 idx := by
  obtain ⟨hlt, hfst⟩ := hL.mem i idx hin
  have hiact : idx ∈ mg.active_move_indices_involving_1st (mg.get idx).1 := by
    rw [hfst]
    exact hin
  unfold update_first_step
  dsimp only
  rw [if_neg (by simp)]
  by_cases c : st.vertex_timestamp (mg.get idx).2 ≠ ct ∨
      (st.vertex_timestamp (mg.get idx).2 = ct ∧
        st.update_bits (mg.get idx).2 UPDATE_BITS_SECOND = false)
  · rw [if_pos c, hX.first i idx hi0 hin]
    obtain ⟨st2, e, U2, F2, m2, p2⟩ := heap_insert_inv hU idx hlt hiact
    exact ⟨st2, e, U2, F2, m2, p2⟩
  · rw [if_neg c]
    have c1 : st.vertex_timestamp (mg.get idx).2 = ct := by
      by_contra h
      exact c (Or.inl h)
    have c2 : st.update_bits (mg.get idx).2 UPDATE_BITS_SECOND = true := by
      cases h : st.update_bits (mg.get idx).2 UPDATE_BITS_SECOND
      · exact absurd (Or.inr ⟨c1, h⟩) c
      · rfl
    exact ⟨st, rfl, hU, SameFrame.frame_refl st, fun _ h => h,
      fun hx => hU.val idx hx (Or.inr (Or.inr ⟨c2, c1⟩))⟩

/-- The body of the loop of a customer with the second update bit only. -/
theorem update_second_step_ok (i : Int) (hi0 : i ≠ 0) (st : CommonOperator) (m : Nat)
    (hU : UpdInv mg tolerance V ct st)
    (hin : m ∈ mg.get_move_generator_indices_involving_2nd i) :
    ∃ st2, update_second_step T mg tolerance false s ct i (T.prepare_cache2 s i) st m =
        some st2 ∧ UpdInv mg tolerance V ct st2 ∧ SameFrame st2 st ∧
      (∀ x, Correct V st x → Correct V st2 x) ∧ Correct V st2 m := by
  obtain ⟨hlt, hact, -, -⟩ := second_view hL hin
  unfold update_second_step
  dsimp only
  rw [if_neg (by simp)]
  by_cases c : st.vertex_timestamp (mg.get m).1 ≠ ct ∨
      (st.vertex_timestamp (mg.get m).1 = ct ∧
        st.update_bits (mg.get m).1 UPDATE_BITS_FIRST = false)
  · rw [if_pos c, hX.second i m hi0 hin]
    obtain ⟨st2, e, U2, F2, m2, p2⟩ := heap_insert_inv hU m hlt hact
    exact ⟨st2, e, U2, F2, m2, p2⟩
  · rw [if_neg c]
    have c1 : st.vertex_timestamp (mg.get m).1 = ct := by
      by_contra h
      exact c (Or.inl h)
    have c2 : st.update_bits (mg.get m).1 UPDATE_BITS_FIRST = true := by
      cases h : st.update_bits (mg.get m).1 UPDATE_BITS_FIRST
      · exact absurd (Or.inr ⟨c1, h⟩) c
      · rfl
    exact ⟨st, rfl, hU, SameFrame.frame_refl st, fun _ h => h,
      fun hx => hU.val m hx (Or.inr (Or.inl ⟨c2, c1⟩))⟩

/-- The body of the loop of the depot with both update bits. -/
theorem update_both_depot_step_ok (st : CommonOperator) (idx : Nat)
    (hU : UpdInv mg tolerance V ct st) (hin : idx ∈ mg.active_move_indices_involving_1st 0) :
    ∃ st2, update_both_depot_step T mg tolerance false s ct 0 st idx = some st2 ∧
      UpdInv mg tolerance V ct st2 ∧ SameFrame st2 st ∧
      (∀ x, Correct V st x → Correct V st2 x) ∧ Correct V st2 idx ∧
      Correct V st2 (MoveGenerators.get_twin_move_generator_index idx) := by
  obtain ⟨hlt, hfst⟩ := hL.mem 0 idx hin
  have htw := hL.twin_get idx hlt
  have htlt := hL.twin_lt idx hlt
  have htact : MoveGenerators.get_twin_move_generator_index idx ∈
      mg.active_move_indices_involving_1st
        (mg.get (MoveGenerators.get_twin_move_generator_index idx)).1 := by
    rw [htw]
    exact hL.sym 0 idx hin
  have hiact : idx ∈ mg.active_move_indices_involving_1st (mg.get idx).1 := by
    rw [hfst]
    exact hin
  have hview : MoveGenerators.get_twin_move_generator_index idx ∈
      mg.get_move_generator_indices_involving_2nd 0 := List.mem_map_of_mem _ hin
  have hsec := hX.depot_second _ hview
  rw [htw] at hsec
  unfold update_both_depot_step
  dsimp only
  rw [if_neg (by simp)]
  by_cases c : st.vertex_timestamp (mg.get idx).2 = ct
  · rw [if_pos c]
    cases hF : st.update_bits (mg.get idx).2 UPDATE_BITS_FIRST <;>
      cases hS : st.update_bits (mg.get idx).2 UPDATE_BITS_SECOND
    · rcases hU.marked _ c with h | h
      · rw [hF] at h
        cases h
      · rw [hS] at h
        cases h
    · have hidx : Correct V st idx := fun hx =>
        hU.val idx hx (Or.inr (Or.inr ⟨hS, c⟩))
      rw [if_neg (by simp), if_neg (by simp), if_pos rfl, hsec]
      obtain ⟨st2, e, U2, F2, m2, p2⟩ := heap_insert_inv hU _ htlt htact
      exact ⟨st2, e, U2, F2, m2, m2 idx hidx, p2⟩
    · have htwin : Correct V st (MoveGenerators.get_twin_move_generator_index idx) :=
        fun hx => hU.val _ hx (Or.inr (Or.inl (by rw [htw]; exact ⟨hF, c⟩)))
      rw [if_neg (by simp), if_pos rfl, hX.depot_first idx hin]
      obtain ⟨st2, e, U2, F2, m2, p2⟩ := heap_insert_inv hU idx hlt hiact
      exact ⟨st2, e, U2, F2, m2, p2, m2 _ htwin⟩
    · rw [if_pos (by simp)]
      refine ⟨st, rfl, hU, SameFrame.frame_refl st, fun _ h => h, ?_, ?_⟩
      · exact fun hx => hU.val idx hx (Or.inr (Or.inr ⟨hS, c⟩))
      · exact fun hx => hU.val _ hx (Or.inr (Or.inl (by rw [htw]; exact ⟨hF, c⟩)))
  · rw [if_neg c, hX.depot_pair idx hin]
    obtain ⟨st1, e1, U1, F1, m1, p1⟩ := heap_insert_inv hU idx hlt hiact
    obtain ⟨st2, e2, U2, F2, m2, p2⟩ := heap_insert_inv U1 _ htlt htact
    refine ⟨st2, ?_, U2, F2.frame_trans F1, fun x h => m2 x (m1 x h), m2 idx p1, p2⟩
    dsimp only
    rw [e1]
    exact e2

/-- The body of the loop of the depot with the first update bit only. -/
theorem update_first_depot_step_ok (st : CommonOperator) (idx : Nat)
    (hU : UpdInv mg tolerance V ct st) (hin : idx ∈ mg.active_move_indices_involving_1st 0) :
    ∃ st2, update_first_depot_step T mg tolerance false s ct 0 st idx = some st2 ∧
      UpdInv mg tolerance V ct st2 ∧ SameFrame st2 st ∧
      (∀ x, Correct V st x → Correct V st2 x) ∧ Correct V st2 idx := by
  obtain ⟨hlt, hfst⟩ := hL.mem 0 idx hin
  have hiact : idx ∈ mg.active_move_indices_involving_1st (mg.get idx).1 := by
    rw [hfst]
    exact hin
  unfold update_first_depot_step
  dsimp only
  rw [if_neg (by simp)]
  by_cases c : st.vertex_timestamp (mg.get idx).2 ≠ ct ∨
      (st.vertex_timestamp (mg.get idx).2 = ct ∧
        st.update_bits (mg.get idx).2 UPDATE_BITS_SECOND = false)
  · rw [if_pos c, hX.depot_first idx hin]
    obtain ⟨st2, e, U2, F2, m2, p2⟩ := heap_insert_inv hU idx hlt hiact
    exact ⟨st2, e, U2, F2, m2, p2⟩
  · rw [if_neg c]
    have c1 : st.vertex_timestamp (mg.get idx).2 = ct := by
      by_contra h
      exact c (Or.inl h)
    have c2 : st.update_bits (mg.get idx).2 UPDATE_BITS_SECOND = true := by
      cases h : st.update_bits (mg.get idx).2 UPDATE_BITS_SECOND
      · exact absurd (Or.inr ⟨c1, h⟩) c
      · rfl
    exact ⟨st, rfl, hU, SameFrame.frame_refl st, fun _ h => h,
      fun hx => hU.val idx hx (Or.inr (Or.inr ⟨c2, c1⟩))⟩

/-- The body of the loop of the depot with the second update bit only. -/
theorem update_second_depot_step_ok (st : CommonOperator) (m : Nat)
    (hU : UpdInv mg tolerance V ct st)
    (hin : m ∈ mg.get_move_generator_indices_involving_2nd 0) :
    ∃ st2, update_second_depot_step T mg tolerance false s ct 0 st m = some st2 ∧
      UpdInv mg tolerance V ct st2 ∧ SameFrame st2 st ∧
      (∀ x, Correct V st x → Correct V st2 x) ∧ Correct V st2 m := by
  obtain ⟨hlt, hact, -, -⟩ := second_view hL hin
  unfold update_second_depot_step
  dsimp only
  rw [if_neg (by simp)]
  by_cases c : st.vertex_timestamp (mg.get m).1 ≠ ct ∨
      (st.vertex_timestamp (mg.get m).1 = ct ∧
        st.update_bits (mg.get m).1 UPDATE_BITS_FIRST = false)
  · rw [if_pos c, hX.depot_second m hin]
    obtain ⟨st2, e, U2, F2, m2, p2⟩ := heap_insert_inv hU m hlt hact
    exact ⟨st2, e, U2, F2, m2, p2⟩
  · rw [if_neg c]
    have c1 : st.vertex_timestamp (mg.get m).1 = ct := by
      by_contra h
      exact c (Or.inl h)
    have c2 : st.update_bits (mg.get m).1 UPDATE_BITS_FIRST = true := by
      cases h : st.update_bits (mg.get m).1 UPDATE_BITS_FIRST
      · exact absurd (Or.inr ⟨c1, h⟩) c
      · rfl
    exact ⟨st, rfl, hU, SameFrame.frame_refl st, fun _ h => h,
      fun hx => hU.val m hx (Or.inr (Or.inl ⟨c2, c1⟩))⟩

end Steps


/-- After the loop of a vertex `i` that carries an update bit, the vertex is stamped: the
invariant of the update holds again when the loop has set right the deltas of the moves of
the active list of `i` (if `i` carries the first bit) and of their twins (if it carries the
second one). -/
theorem UpdInv.after_stamp {mg : MoveGenerators} (hL : mg.Lists) {tolerance : Int}
    {V : Nat → Int} {ct : Nat} {st : CommonOperator} (hU : UpdInv mg tolerance V ct st)
    (i : Int)
    (hbit : st.update_bits i UPDATE_BITS_FIRST = true ∨
      st.update_bits i UPDATE_BITS_SECOND = true)
    (hF : st.update_bits i UPDATE_BITS_FIRST = true →
      ∀ idx ∈ mg.active_move_indices_involving_1st i, Correct V st idx)
    (hS : st.update_bits i UPDATE_BITS_SECOND = true →
      ∀ idx ∈ mg.active_move_indices_involving_1st i,
        Correct V st (MoveGenerators.get_twin_move_generator_index idx)) :
    UpdInv mg tolerance V ct (st.stamp i ct) := by
  refine ⟨hU.heap_ok, hU.act, hU.low, ?_, ?_⟩
  · intro m hm hdone
    have hm2 : st.heap.heap_index m ≠ -1 := hm
    show st.heap.delta m = V m
    obtain ⟨hlt, hact⟩ := hU.act m hm2
    rcases hdone with h | ⟨h1, h2⟩ | ⟨h1, h2⟩
    · exact hU.val m hm2 (Or.inl h)
    · have h1b : st.update_bits (mg.get m).1 UPDATE_BITS_FIRST = true := h1
      have h2b : upd st.vertex_timestamp i ct (mg.get m).1 = ct := h2
      by_cases c : (mg.get m).1 = i
      · rw [c] at h1b hact
        exact hF h1b m hact hm2
      · rw [upd_other _ _ _ _ c] at h2b
        exact hU.val m hm2 (Or.inr (Or.inl ⟨h1b, h2b⟩))
    · have h1b : st.update_bits (mg.get m).2 UPDATE_BITS_SECOND = true := h1
      have h2b : upd st.vertex_timestamp i ct (mg.get m).2 = ct := h2
      by_cases c : (mg.get m).2 = i
      · have hs := hL.sym _ m hact
        rw [c] at h1b hs
        have := hS h1b _ hs
        rw [MoveGenerators.twin_twin] at this
        exact this hm2
      · rw [upd_other _ _ _ _ c] at h2b
        exact hU.val m hm2 (Or.inr (Or.inr ⟨h1b, h2b⟩))
  · intro v hv
    have hv2 : upd st.vertex_timestamp i ct v = ct := hv
    show st.update_bits v UPDATE_BITS_FIRST = true ∨ st.update_bits v UPDATE_BITS_SECOND = true
    by_cases c : v = i
    · rw [c]
      exact hbit
    · rw [upd_other _ _ _ _ c] at hv2
      exact hU.marked v hv2

end CommonOperator
namespace CommonOperator

section Loops

variable {K12 K1 K2 : Type} {T : AbstractOperator K12 K1 K2} {mg : MoveGenerators}
  (hL : mg.Lists) {tolerance : Int} {s : Solution} {V : Nat → Int} {ct : Nat}
  (hX : UpdExact T mg s V)
include hL hX

/-- The loop of `asymmetric_update` for a customer `i` that carries an update bit, followed
by the stamp of `i`. -/
theorem update_customer_ok (i : Int) (hi0 : i ≠ 0) (st : CommonOperator)
    (hU : UpdInv mg tolerance V ct st)
    (hbit : st.update_bits i UPDATE_BITS_FIRST = true ∨
      st.update_bits i UPDATE_BITS_SECOND = true) :
    ∃ st2,
      (if (st.update_bits i UPDATE_BITS_FIRST && st.update_bits i UPDATE_BITS_SECOND) = true
        then (mg.get_move_generator_indices_involving_1st i).foldlM
          (update_both_step T mg tolerance false s ct i (T.prepare_cache12 s i)) st
        else if st.update_bits i UPDATE_BITS_FIRST = true then
          (mg.get_move_generator_indices_involving_1st i).foldlM
            (update_first_step T mg tolerance false s ct i (T.prepare_cache1 s i)) st
        else if st.update_bits i UPDATE_BITS_SECOND = true then
          (mg.get_move_generator_indices_involving_2nd i).foldlM
            (update_second_step T mg tolerance false s ct i (T.prepare_cache2 s i)) st
        else some st) = some st2 ∧
      UpdInv mg tolerance V ct (st2.stamp i ct) ∧ SameFrame st2 st := by
  cases hF : st.update_bits i UPDATE_BITS_FIRST <;>
    cases hS : st.update_bits i UPDATE_BITS_SECOND
  · rw [hF, hS] at hbit
    rcases hbit with h | h <;> cases h
  · rw [if_neg (by simp), if_neg (by simp), if_pos rfl]
    obtain ⟨st2, e, ⟨U2, F2⟩, -, p2⟩ := fold_progress
      (J := fun x => UpdInv mg tolerance V ct x ∧ SameFrame x st)
      (Q := fun m x => Correct V x m)
      (L := mg.get_move_generator_indices_involving_2nd i)
      (fun x m hI hm => by
        obtain ⟨x2, e, U, F, mo, p⟩ := update_second_step_ok hL hX i hi0 x m hI.1 hm
        exact ⟨x2, e, ⟨U, F.frame_trans hI.2⟩, mo, p⟩)
      (mg.get_move_generator_indices_involving_2nd i) st ⟨hU, SameFrame.frame_refl st⟩
      (fun x hx => hx)
    refine ⟨st2, e, U2.after_stamp hL i ?_ ?_ ?_, F2⟩
    · rw [F2.2.2.1, hS]
      exact Or.inr rfl
    · rw [F2.2.2.1, hF]
      intro h
      cases h
    · intro _ idx hidx
      exact p2 _ (List.mem_map_of_mem _ hidx)
  · rw [if_neg (by simp), if_pos rfl]
    obtain ⟨st2, e, ⟨U2, F2⟩, -, p2⟩ := fold_progress
      (J := fun x => UpdInv mg tolerance V ct x ∧ SameFrame x st)
      (Q := fun m x => Correct V x m)
      (L := mg.active_move_indices_involving_1st i)
      (fun x m hI hm => by
        obtain ⟨x2, e, U, F, mo, p⟩ := update_first_step_ok hL hX i hi0 x m hI.1 hm
        exact ⟨x2, e, ⟨U, F.frame_trans hI.2⟩, mo, p⟩)
      (mg.active_move_indices_involving_1st i) st ⟨hU, SameFrame.frame_refl st⟩
      (fun x hx => hx)
    refine ⟨st2, e, U2.after_stamp hL i ?_ ?_ ?_, F2⟩
    · rw [F2.2.2.1, hF]
      exact Or.inl rfl
    · intro _ idx hidx
      exact p2 _ hidx
    · rw [F2.2.2.1, hS]
      intro h
      cases h
  · rw [if_pos (by simp)]
    obtain ⟨st2, e, ⟨U2, F2⟩, -, p2⟩ := fold_progress
      (J := fun x => UpdInv mg tolerance V ct x ∧ SameFrame x st)
      (Q := fun m x => Correct V x m ∧
        Correct V x (MoveGenerators.get_twin_move_generator_index m))
      (L := mg.active_move_indices_involving_1st i)
      (fun x m hI hm => by
        obtain ⟨x2, e, U, F, mo, p, q⟩ := update_both_step_ok hL hX i hi0 x m hI.1 hm
        exact ⟨x2, e, ⟨U, F.frame_trans hI.2⟩, fun y hy => ⟨mo _ hy.1, mo _ hy.2⟩, p, q⟩)
      (mg.active_move_indices_involving_1st i) st ⟨hU, SameFrame.frame_refl st⟩
      (fun x hx => hx)
    refine ⟨st2, e, U2.after_stamp hL i ?_ ?_ ?_, F2⟩
    · rw [F2.2.2.1, hF]
      exact Or.inl rfl
    · intro _ idx hidx
      exact (p2 _ hidx).1
    · intro _ idx hidx
      exact (p2 _ hidx).2

/-- The part of `asymmetric_update` for the depot when it carries an update bit. -/
theorem asymmetric_update_depot_ok (st : CommonOperator) (hU : UpdInv mg tolerance V ct st)
    (hbit : st.update_bits 0 UPDATE_BITS_FIRST = true ∨
      st.update_bits 0 UPDATE_BITS_SECOND = true) :
    ∃ st2, asymmetric_update_depot T mg tolerance false s ct st = some st2 ∧
      UpdInv mg tolerance V ct st2 ∧ st2.vertex_timestamp = upd st.vertex_timestamp 0 ct ∧
      SameRest st2 st := by
  unfold asymmetric_update_depot
  dsimp only
  cases hF : st.update_bits 0 UPDATE_BITS_FIRST <;>
    cases hS : st.update_bits 0 UPDATE_BITS_SECOND
  · rw [hF, hS] at hbit
    rcases hbit with h | h <;> cases h
  · rw [if_neg (by simp), if_neg (by simp), if_pos rfl]
    obtain ⟨st2, e, ⟨U2, F2⟩, -, p2⟩ := fold_progress
      (J := fun x => UpdInv mg tolerance V ct x ∧ SameFrame x st)
      (Q := fun m x => Correct V x m)
      (L := mg.get_move_generator_indices_involving_2nd 0)
      (fun x m hI hm => by
        obtain ⟨x2, e, U, F, mo, p⟩ := update_second_depot_step_ok hL hX x m hI.1 hm
        exact ⟨x2, e, ⟨U, F.frame_trans hI.2⟩, mo, p⟩)
      (mg.get_move_generator_indices_involving_2nd 0) st ⟨hU, SameFrame.frame_refl st⟩
      (fun x hx => hx)
    rw [e]
    refine ⟨_, rfl, U2.after_stamp hL 0 ?_ ?_ ?_, ?_, F2.2.1, F2.2.2.1, F2.2.2.2⟩
    · rw [F2.2.2.1, hS]
      exact Or.inr rfl
    · rw [F2.2.2.1, hF]
      intro h
      cases h
    · intro _ idx hidx
      exact p2 _ (List.mem_map_of_mem _ hidx)
    · show upd st2.vertex_timestamp 0 ct = upd st.vertex_timestamp 0 ct
      rw [F2.1]
  · rw [if_neg (by simp), if_pos rfl]
    obtain ⟨st2, e, ⟨U2, F2⟩, -, p2⟩ := fold_progress
      (J := fun x => UpdInv mg tolerance V ct x ∧ SameFrame x st)
      (Q := fun m x => Correct V x m)
      (L := mg.active_move_indices_involving_1st 0)
      (fun x m hI hm => by
        obtain ⟨x2, e, U, F, mo, p⟩ := update_first_depot_step_ok hL hX x m hI.1 hm
        exact ⟨x2, e, ⟨U, F.frame_trans hI.2⟩, mo, p⟩)
      (mg.active_move_indices_involving_1st 0) st ⟨hU, SameFrame.frame_refl st⟩
      (fun x hx => hx)
    have e' : (mg.get_move_generator_indices_involving_1st 0).foldlM
      (update_first_depot_step T mg tolerance false s ct 0) st = some st2 := e
    rw [e']
    refine ⟨_, rfl, U2.after_stamp hL 0 ?_ ?_ ?_, ?_, F2.2.1, F2.2.2.1, F2.2.2.2⟩
    · rw [F2.2.2.1, hF]
      exact Or.inl rfl
    · intro _ idx hidx
      exact p2 _ hidx
    · rw [F2.2.2.1, hS]
      intro h
      cases h
    · show upd st2.vertex_timestamp 0 ct = upd st.vertex_timestamp 0 ct
      rw [F2.1]
  · rw [if_pos (by simp)]
    obtain ⟨st2, e, ⟨U2, F2⟩, -, p2⟩ := fold_progress
      (J := fun x => UpdInv mg tolerance V ct x ∧ SameFrame x st)
      (Q := fun m x => Correct V x m ∧
        Correct V x (MoveGenerators.get_twin_move_generator_index m))
      (L := mg.active_move_indices_involving_1st 0)
      (fun x m hI hm => by
        obtain ⟨x2, e, U, F, mo, p, q⟩ := update_both_depot_step_ok hL hX x m hI.1 hm
        exact ⟨x2, e, ⟨U, F.frame_trans hI.2⟩, fun y hy => ⟨mo _ hy.1, mo _ hy.2⟩, p, q⟩)
      (mg.active_move_indices_involving_1st 0) st ⟨hU, SameFrame.frame_refl st⟩
      (fun x hx => hx)
    have e' : (mg.get_move_generator_indices_involving_1st 0).foldlM
      (update_both_depot_step T mg tolerance false s ct 0) st = some st2 := e
    rw [e']
    refine ⟨_, rfl, U2.after_stamp hL 0 ?_ ?_ ?_, ?_, F2.2.1, F2.2.2.1, F2.2.2.2⟩
    · rw [F2.2.2.1, hF]
      exact Or.inl rfl
    · intro _ idx hidx
      exact (p2 _ hidx).1
    · intro _ idx hidx
      exact (p2 _ hidx).2
    · show upd st2.vertex_timestamp 0 ct = upd st.vertex_timestamp 0 ct
      rw [F2.1]

/-- The body of the loop of `asymmetric_update` over the affected vertices, for a vertex
that carries an update bit. -/
theorem asymmetric_update_vertex_ok (acc : CommonOperator × Bool) (i : Int)
    (hU : UpdInv mg tolerance V ct acc.1)
    (hbit : acc.1.update_bits i UPDATE_BITS_FIRST = true ∨
      acc.1.update_bits i UPDATE_BITS_SECOND = true) :
    ∃ acc2, asymmetric_update_vertex T mg tolerance false s ct acc i = some acc2 ∧
      UpdInv mg tolerance V ct acc2.1 ∧ SameRest acc2.1 acc.1 ∧
      acc2.1.vertex_timestamp =
        (if i = 0 then acc.1.vertex_timestamp else upd acc.1.vertex_timestamp i ct) ∧
      acc2.2 = (if i = 0 then true else acc.2) := by
  unfold asymmetric_update_vertex
  rw [if_neg (by simp)]
  by_cases c : i = 0
  · rw [if_pos c, if_pos c, if_pos c]
    exact ⟨_, rfl, hU, SameRest.rest_refl _, rfl, rfl⟩
  · rw [if_neg c, if_neg c, if_neg c]
    obtain ⟨st2, e, U2, F2⟩ := update_customer_ok hL hX i c acc.1 hU hbit
    dsimp only
    rw [e]
    refine ⟨_, rfl, U2, ⟨F2.2.1, F2.2.2.1, F2.2.2.2⟩, ?_, rfl⟩
    show upd st2.vertex_timestamp i ct = upd acc.1.vertex_timestamp i ct
    rw [F2.1]

/-- The loop of `asymmetric_update` over the affected vertices. -/
theorem update_outer_fold :
    ∀ (rest : List Int) (acc : CommonOperator × Bool), UpdInv mg tolerance V ct acc.1 →
      (∀ v ∈ rest, acc.1.update_bits v UPDATE_BITS_FIRST = true ∨
        acc.1.update_bits v UPDATE_BITS_SECOND = true) →
      ∃ acc2, rest.foldlM (asymmetric_update_vertex T mg tolerance false s ct) acc =
          some acc2 ∧
        UpdInv mg tolerance V ct acc2.1 ∧ SameRest acc2.1 acc.1 ∧
        (∀ v, v ∈ rest → v ≠ 0 → acc2.1.vertex_timestamp v = ct) ∧
        (∀ v, acc2.1.vertex_timestamp v = acc.1.vertex_timestamp v ∨
          acc2.1.vertex_timestamp v = ct) ∧
        (acc2.2 = true ↔ acc.2 = true ∨ (0 : Int) ∈ rest) := by
  intro rest
  induction rest with
  | nil =>
    intro acc hU _
    exact ⟨acc, rfl, hU, SameRest.rest_refl _, fun v hv => absurd hv (List.not_mem_nil v),
      fun v => Or.inl rfl, by simp⟩
  | cons i rest ih =>
    intro acc hU hbits
    obtain ⟨acc1, e1, U1, R1, t1, f1⟩ := asymmetric_update_vertex_ok hL hX acc i hU
      (hbits i (List.mem_cons_self _ _))
    have R1b : acc1.1.update_bits = acc.1.update_bits := R1.2.1
    obtain ⟨acc2, e2, U2, R2, s2, t2, f2⟩ := ih acc1 U1 (fun v hv => by
      rw [R1b]
      exact hbits v (List.mem_cons_of_mem _ hv))
    have hstep : ∀ v, acc1.1.vertex_timestamp v = acc.1.vertex_timestamp v ∨
        acc1.1.vertex_timestamp v = ct := by
      intro v
      rw [t1]
      by_cases c : i = 0
      · rw [if_pos c]
        exact Or.inl rfl
      · rw [if_neg c]
        by_cases cv : v = i
        · rw [cv, upd_same]
          exact Or.inr rfl
        · rw [upd_other _ _ _ _ cv]
          exact Or.inl rfl
    refine ⟨acc2, ?_, U2, R2.rest_trans R1, ?_, ?_, ?_⟩
    · rw [List.foldlM_cons, e1]
      exact e2
    · intro v hv hv0
      rcases List.mem_cons.1 hv with c | c
      · have h1 : acc1.1.vertex_timestamp v = ct := by
          rw [t1, if_neg (c ▸ hv0), c, upd_same]
        rcases t2 v with h | h
        · rw [h]
          exact h1
        · exact h
      · exact s2 v c hv0
    · intro v
      rcases t2 v with h | h
      · rcases hstep v with h2 | h2
        · exact Or.inl (h.trans h2)
        · exact Or.inr (h.trans h2)
      · exact Or.inr h
    · rw [f2, f1]
      by_cases c : i = 0
      · rw [if_pos c, c]
        simp
      · rw [if_neg c]
        have hne : (0 : Int) ≠ i := fun e => c e.symm
        simp [hne]

end Loops

/-- The last loop of `asymmetric_update`: both update bits of the vertices of the list are
reset, the other bits are kept. -/
theorem reset_fold (l : List Int) (bits : Int → Nat → Bool) (v : Int) (k : Nat) :
    l.foldl (fun bits i => set_update_bit (set_update_bit bits i UPDATE_BITS_FIRST false) i
      UPDATE_BITS_SECOND false) bits v k =
    if v ∈ l ∧ (k = UPDATE_BITS_FIRST ∨ k = UPDATE_BITS_SECOND) then false else bits v k := by
  induction l generalizing bits with
  | nil => simp
  | cons i l ih =>
    rw [List.foldl_cons, ih]
    unfold set_update_bit upd UPDATE_BITS_FIRST UPDATE_BITS_SECOND
    by_cases c1 : v = i <;> by_cases c2 : v ∈ l <;> by_cases c3 : k = 0 <;>
      by_cases c4 : k = 1 <;> simp [c1, c2, c3, c4]

section Update

variable {K12 K1 K2 : Type} {T : AbstractOperator K12 K1 K2} {mg : MoveGenerators}
  (hL : mg.Lists) {tolerance : Int} {s : Solution} {V : Nat → Int}
  (hX : UpdExact T mg s V)
include hL hX

/-- Method `asymmetric_update` on a state in which the update bits mark the affected
vertices and the deltas of the moves of the heap that the bits do not cover are those of
the current solution: it returns, and every move of the heap has the delta of the current
solution, which is not above `-tolerance`; the update bits are reset. -/
theorem asymmetric_update_ok (st : CommonOperator) (hok : st.heap.OK)
    (hact : ∀ m, st.heap.heap_index m ≠ -1 →
      m < mg.size ∧ m ∈ mg.active_move_indices_involving_1st (mg.get m).1)
    (hlow : ∀ m, st.heap.heap_index m ≠ -1 → st.heap.delta m ≤ -tolerance)
    (hclean : ∀ m, st.heap.heap_index m ≠ -1 →
      st.update_bits (mg.get m).1 UPDATE_BITS_FIRST = false →
      st.update_bits (mg.get m).2 UPDATE_BITS_SECOND = false → st.heap.delta m = V m)
    (hts : ∀ v, st.vertex_timestamp v ≤ st.timegen)
    (hbits : ∀ v ∈ st.affected_vertices.get_elements,
      st.update_bits v UPDATE_BITS_FIRST = true ∨ st.update_bits v UPDATE_BITS_SECOND = true)
    (hbits2 : ∀ v k, st.update_bits v k = true →
      v ∈ st.affected_vertices.get_elements ∧ (k = UPDATE_BITS_FIRST ∨ k = UPDATE_BITS_SECOND)) :
    ∃ st2, asymmetric_update T mg tolerance false s st = some st2 ∧ st2.heap.OK ∧
      (∀ m, st2.heap.heap_index m ≠ -1 →
        m < mg.size ∧ m ∈ mg.active_move_indices_involving_1st (mg.get m).1) ∧
      (∀ m, st2.heap.heap_index m ≠ -1 → st2.heap.delta m ≤ -tolerance) ∧
      (∀ m, st2.heap.heap_index m ≠ -1 → st2.heap.delta m = V m) ∧
      (∀ v, st2.vertex_timestamp v ≤ st2.timegen) ∧
      (∀ v k, st2.update_bits v k = false) ∧
      st2.affected_vertices = st.affected_vertices := by
  have hU0 : UpdInv mg tolerance V (st.timegen + 1) st := by
    refine ⟨hok, hact, hlow, ?_, ?_⟩
    · intro m hm hdone
      rcases hdone with ⟨h1, h2⟩ | ⟨-, h⟩ | ⟨-, h⟩
      · exact hclean m hm h1 h2
      · have := hts (mg.get m).1
        omega
      · have := hts (mg.get m).2
        omega
    · intro v hv
      have := hts v
      omega
  obtain ⟨acc1, e1, U1, R1, s1, t1, f1⟩ := update_outer_fold hL hX
    st.affected_vertices.get_elements (st, false) hU0 hbits
  obtain ⟨st1, depot⟩ := acc1
  have R1b : st1.timegen = st.timegen ∧ st1.update_bits = st.update_bits ∧
      st1.affected_vertices = st.affected_vertices := R1
  have s1b : ∀ v, v ∈ st.affected_vertices.get_elements → v ≠ 0 →
      st1.vertex_timestamp v = st.timegen + 1 := s1
  have t1b : ∀ v, st1.vertex_timestamp v = st.vertex_timestamp v ∨
      st1.vertex_timestamp v = st.timegen + 1 := t1
  have f1b : depot = true ↔ (0 : Int) ∈ st.affected_vertices.get_elements := by
    have : depot = true ↔ false = true ∨ (0 : Int) ∈ st.affected_vertices.get_elements := f1
    simpa using this
  have U1b : UpdInv mg tolerance V (st.timegen + 1) st1 := U1
  -- the part for the depot
  have hdep : ∃ st2, (if depot = true then
        asymmetric_update_depot T mg tolerance false s (st.timegen + 1) st1
        else some st1) = some st2 ∧
      UpdInv mg tolerance V (st.timegen + 1) st2 ∧ SameRest st2 st ∧
      (∀ v, v ∈ st.affected_vertices.get_elements → st2.vertex_timestamp v = st.timegen + 1) ∧
      (∀ v, st2.vertex_timestamp v ≤ st.timegen + 1) := by
    by_cases c : depot = true
    · rw [if_pos c]
      have h0 := f1b.1 c
      have hb := hbits 0 h0
      rw [← R1b.2.1] at hb
      obtain ⟨st2, e2, U2, t2, R2⟩ := asymmetric_update_depot_ok hL hX st1 U1b hb
      refine ⟨st2, e2, U2, R2.rest_trans R1b, fun v hv => ?_, fun v => ?_⟩
      · rw [t2]
        by_cases cv : v = 0
        · rw [cv, upd_same]
        · rw [upd_other _ _ _ _ cv]
          exact s1b v hv cv
      · rw [t2]
        by_cases cv : v = 0
        · rw [cv, upd_same]
        · rw [upd_other _ _ _ _ cv]
          rcases t1b v with h | h
          · rw [h]
            exact Nat.le_succ_of_le (hts v)
          · rw [h]
    · rw [if_neg c]
      refine ⟨st1, rfl, U1b, R1b, fun v hv => ?_, fun v => ?_⟩
      · by_cases cv : v = 0
        · rw [cv] at hv
          exact absurd (f1b.2 hv) c
        · exact s1b v hv cv
      · rcases t1b v with h | h
        · rw [h]
          exact Nat.le_succ_of_le (hts v)
        · rw [h]
  obtain ⟨st2, e2, U2, R2, s2, t2⟩ := hdep
  refine ⟨st2.reset_update_bits.increment, ?_, U2.heap_ok, U2.act, U2.low, ?_, ?_, ?_, ?_⟩
  · unfold asymmetric_update
    simp only [e1]
    rw [e2]
    rfl
  · intro m hm
    have hm2 : st2.heap.heap_index m ≠ -1 := hm
    show st2.heap.delta m = V m
    refine U2.val m hm2 ?_
    cases hF : st2.update_bits (mg.get m).1 UPDATE_BITS_FIRST
    · cases hS : st2.update_bits (mg.get m).2 UPDATE_BITS_SECOND
      · exact Or.inl ⟨rfl, rfl⟩
      · right
        right
        refine ⟨rfl, s2 _ ?_⟩
        rw [R2.2.1] at hS
        exact (hbits2 _ _ hS).1
    · right
      left
      refine ⟨rfl, s2 _ ?_⟩
      rw [R2.2.1] at hF
      exact (hbits2 _ _ hF).1
  · intro v
    show st2.vertex_timestamp v ≤ st2.timegen + 1
    rw [R2.1]
    exact t2 v
  · intro v k
    show (st2.affected_vertices.get_elements.foldl _ st2.update_bits) v k = false
    rw [reset_fold, R2.2.1, R2.2.2]
    by_cases c : v ∈ st.affected_vertices.get_elements ∧
        (k = UPDATE_BITS_FIRST ∨ k = UPDATE_BITS_SECOND)
    · rw [if_pos c]
    · rw [if_neg c]
      cases h : st.update_bits v k
      · rfl
      · exact absurd (hbits2 v k h) c
  · exact R2.2.2

end Update

end CommonOperator
/-! ## The deltas that the local search computes for OneOneExchange -/

/-- The edge cost stored for a move is the cost of the arc between its vertices. -/
theorem MoveGenerators.Lists.edge_cost {I : Instance} {mg : MoveGenerators} (hL : mg.Lists)
    (hc : mg.CostsOK I) (hsym : CostSym I) {idx : Nat} (hlt : idx < mg.size) :
    mg.get_edge_cost idx = I.cost (mg.get idx).1 (mg.get idx).2 := by
  have hget : ∀ k, k < mg.size → mg.moves[k]? = some (mg.get k) := by
    intro k hk
    unfold MoveGenerators.get
    have hk2 : k < mg.moves.length := hk
    rw [List.getD_eq_getElem?_getD, List.getElem?_eq_getElem hk2]
    rfl
  have hcost : ∀ m a b, mg.moves[2 * m]? = some (a, b) →
      mg.edge_costs.getD m 0 = I.cost a b := by
    intro m a b e
    have := hc.2 m a b e
    rw [List.getD_eq_getElem?_getD, this]
    rfl
  unfold MoveGenerators.get_edge_cost
  rcases MoveGenerators.twin_cases idx with ⟨hp, e⟩ | ⟨hp, e⟩
  · have e2 : idx = 2 * (idx / 2) := by omega
    have h1 := hget idx hlt
    have h2 : mg.moves[2 * (idx / 2)]? = some (mg.get idx) := by
      rw [← e2]
      exact h1
    exact hcost _ _ _ h2
  · have e2 : MoveGenerators.get_twin_move_generator_index idx = 2 * (idx / 2) := by omega
    have h1 := hget _ (hL.twin_lt idx hlt)
    rw [hL.twin_get idx hlt] at h1
    have h2 : mg.moves[2 * (idx / 2)]? = some ((mg.get idx).2, (mg.get idx).1) := by
      rw [← e2]
      exact h1
    rw [hcost _ _ _ h2]
    exact hsym.1 _ _

namespace OneOneExchange

section Caches

variable {I : Instance} {s : Solution} {A : Nat → List Int}

theorem cache1_of_fields (s : Solution) (v o : Int) :
    (cache1_of s v o).v = (cache_of s v o).v ∧ (cache1_of s v o).prev = (cache_of s v o).prev ∧
    (cache1_of s v o).next = (cache_of s v o).next ∧
    (cache1_of s v o).vrem = (cache_of s v o).vrem := by
  unfold cache1_of cache_of
  by_cases c : v = 0
  · rw [if_pos c, if_pos c]
    exact ⟨rfl, rfl, rfl, rfl⟩
  · rw [if_neg c, if_neg c]
    exact ⟨rfl, rfl, rfl, rfl⟩

theorem cache2_of_fields (s : Solution) (v o : Int) :
    (cache2_of s v o).v = (cache_of s v o).v ∧ (cache2_of s v o).prev = (cache_of s v o).prev ∧
    (cache2_of s v o).prevprev = (cache_of s v o).prevprev ∧
    (cache2_of s v o).prevrem = (cache_of s v o).prevrem := by
  unfold cache2_of cache_of
  by_cases c : v = 0
  · rw [if_pos c, if_pos c]
    exact ⟨rfl, rfl, rfl, rfl⟩
  · rw [if_neg c, if_neg c]
    exact ⟨rfl, rfl, rfl, rfl⟩

/-- The instances of the template `compute_cost(move, i, j)` give the value of
`compute_cost(solution, move)` on the caches of the endpoints. -/
theorem cached_variants (hsym : CostSym I) (hR : Rep I s A)
    (hdep : ∀ r, A r ≠ [] → (0 : Int) ∈ A r) {a b : Int} (hab : a ≠ b)
    (ha : a ≠ 0 → (s.customers_list a).route_ptr ≠ 0)
    (hb : b ≠ 0 → (s.customers_list b).route_ptr ≠ 0) :
    compute_cost_12_2 I (I.cost a b) (cache_of s a b) (cache2_of s b a) =
      compute_cost I s a b ∧
    compute_cost_1_12 I (I.cost a b) (cache1_of s a b) (cache_of s b a) =
      compute_cost I s a b ∧
    compute_cost_1_2 I (I.cost a b) (cache1_of s a b) (cache2_of s b a) =
      compute_cost I s a b := by
  obtain ⟨h, -⟩ := cached_cost_eq hsym hR hdep hab ha hb
  obtain ⟨a1, a2, a3, a4⟩ := cache1_of_fields s a b
  obtain ⟨b1, b2, b3, b4⟩ := cache2_of_fields s b a
  unfold compute_cost_cached at h
  unfold compute_cost_12_2 compute_cost_1_12 compute_cost_1_2
  rw [a1, a2, a3, a4, b2, b3, b4]
  exact ⟨h, h, h⟩

end Caches

end OneOneExchange
namespace OneOneExchange

section Exact

variable {I : Instance} {s : Solution} {A : Nat → List Int} {mg : MoveGenerators}

theorem cache_of_customer (s : Solution) {v : Int} (o : Int) (h : v ≠ 0) :
    prepare_cache12 s v = cache_of s v o := by
  unfold cache_of
  rw [if_neg h]

theorem cache1_of_customer (s : Solution) {v : Int} (o : Int) (h : v ≠ 0) :
    prepare_cache1 s v = cache1_of s v o := by
  unfold cache1_of
  rw [if_neg h]

theorem cache2_of_customer (s : Solution) {v : Int} (o : Int) (h : v ≠ 0) :
    prepare_cache2 s v = cache2_of s v o := by
  unfold cache2_of
  rw [if_neg h]

/-- What the local search knows of a move of the registry: its endpoints are distinct and
served, and the edge cost stored for it and for its twin is the cost of the arc between
them. -/
theorem move_facts (hsym : CostSym I) (hL : mg.Lists) (hc : mg.CostsOK I)
    (hserved : ∀ idx, idx < mg.size →
      ((mg.get idx).1 ≠ 0 → (s.customers_list (mg.get idx).1).route_ptr ≠ 0) ∧
      ((mg.get idx).2 ≠ 0 → (s.customers_list (mg.get idx).2).route_ptr ≠ 0))
    {idx : Nat} (hlt : idx < mg.size) :
    (mg.get idx).1 ≠ (mg.get idx).2 ∧
    ((mg.get idx).1 ≠ 0 → (s.customers_list (mg.get idx).1).route_ptr ≠ 0) ∧
    ((mg.get idx).2 ≠ 0 → (s.customers_list (mg.get idx).2).route_ptr ≠ 0) ∧
    mg.get_edge_cost idx = I.cost (mg.get idx).1 (mg.get idx).2 ∧
    mg.get_edge_cost (MoveGenerators.get_twin_move_generator_index idx) =
      I.cost (mg.get idx).1 (mg.get idx).2 ∧
    mg.get (MoveGenerators.get_twin_move_generator_index idx) =
      ((mg.get idx).2, (mg.get idx).1) := by
  refine ⟨hL.ne idx hlt, (hserved idx hlt).1, (hserved idx hlt).2, hL.edge_cost hc hsym hlt,
    ?_, hL.twin_get idx hlt⟩
  rw [hL.edge_cost hc hsym (hL.twin_lt idx hlt), hL.twin_get idx hlt]
  exact hsym.1 _ _

/-- The deltas that `asymmetric_update` computes for OneOneExchange are the values of
`compute_cost` on the solution. -/
theorem operator_upd_exact (hsym : CostSym I) (hL : mg.Lists) (hc : mg.CostsOK I)
    (hR : Rep I s A) (hdep : ∀ r, A r ≠ [] → (0 : Int) ∈ A r)
    (hserved : ∀ idx, idx < mg.size →
      ((mg.get idx).1 ≠ 0 → (s.customers_list (mg.get idx).1).route_ptr ≠ 0) ∧
      ((mg.get idx).2 ≠ 0 → (s.customers_list (mg.get idx).2).route_ptr ≠ 0)) :
    CommonOperator.UpdExact (operator I mg) mg s
      (fun m => compute_cost I s (mg.get m).1 (mg.get m).2) := by
  have key : ∀ idx, idx < mg.size →
      compute_cost_12_2 I (mg.get_edge_cost idx) (cache_of s (mg.get idx).1 (mg.get idx).2)
        (cache2_of s (mg.get idx).2 (mg.get idx).1) =
        compute_cost I s (mg.get idx).1 (mg.get idx).2 ∧
      compute_cost_1_12 I (mg.get_edge_cost idx) (cache1_of s (mg.get idx).1 (mg.get idx).2)
        (cache_of s (mg.get idx).2 (mg.get idx).1) =
        compute_cost I s (mg.get idx).1 (mg.get idx).2 ∧
      compute_cost_1_2 I (mg.get_edge_cost idx) (cache1_of s (mg.get idx).1 (mg.get idx).2)
        (cache2_of s (mg.get idx).2 (mg.get idx).1) =
        compute_cost I s (mg.get idx).1 (mg.get idx).2 ∧
      compute_cost_pair I (mg.get_edge_cost idx) (cache_of s (mg.get idx).1 (mg.get idx).2)
        (cache_of s (mg.get idx).2 (mg.get idx).1) =
        (compute_cost I s (mg.get idx).1 (mg.get idx).2,
          compute_cost I s (mg.get idx).2 (mg.get idx).1) := by
    intro idx hlt
    obtain ⟨hne, h1, h2, he, -, -⟩ := move_facts hsym hL hc hserved hlt
    obtain ⟨v1, v2, v3⟩ := cached_variants hsym hR hdep hne h1 h2
    rw [he]
    exact ⟨v1, v2, v3, (cached_cost_eq hsym hR hdep hne h1 h2).2⟩
  constructor
  · intro i idx hi0 hin
    obtain ⟨hlt, hfst⟩ := hL.mem i idx hin
    have := (key idx hlt).1
    rw [hfst] at this
    show compute_cost_12_2 I (mg.get_edge_cost idx) (prepare_cache12 s i)
      (cache2_of s (mg.get idx).2 i) = compute_cost I s (mg.get idx).1 (mg.get idx).2
    rw [cache_of_customer s (mg.get idx).2 hi0, hfst]
    exact this
  · intro i idx hi0 hin
    obtain ⟨hlt, hfst⟩ := hL.mem i idx hin
    have htw := hL.twin_get idx hlt
    have := (key _ (hL.twin_lt idx hlt)).2.1
    rw [htw, hfst] at this
    show compute_cost_1_12 I (mg.get_edge_cost _) (cache1_of s (mg.get idx).2 i)
      (prepare_cache12 s i) = compute_cost I s (mg.get _).1 (mg.get _).2
    rw [cache_of_customer s (mg.get idx).2 hi0, htw, hfst]
    exact this
  · intro i idx hi0 hin
    obtain ⟨hlt, hfst⟩ := hL.mem i idx hin
    have htw := hL.twin_get idx hlt
    obtain ⟨-, -, -, he, he2, -⟩ := move_facts hsym hL hc hserved hlt
    have := (key idx hlt).2.2.2
    rw [he, hfst] at this
    show compute_cost_pair I (mg.get_edge_cost _) (prepare_cache12 s i)
      (cache_of s (mg.get idx).2 i) =
      (compute_cost I s (mg.get idx).1 (mg.get idx).2, compute_cost I s (mg.get _).1 (mg.get _).2)
    rw [cache_of_customer s (mg.get idx).2 hi0, htw, he2, hfst]
    exact this
  · intro i idx hi0 hin
    obtain ⟨hlt, hfst⟩ := hL.mem i idx hin
    have := (key idx hlt).2.2.1
    rw [hfst] at this
    show compute_cost_1_2 I (mg.get_edge_cost idx) (prepare_cache1 s i)
      (cache2_of s (mg.get idx).2 i) = compute_cost I s (mg.get idx).1 (mg.get idx).2
    rw [cache1_of_customer s (mg.get idx).2 hi0, hfst]
    exact this
  · intro i m hi0 hin
    obtain ⟨hlt, -, hsnd, -⟩ := CommonOperator.second_view hL hin
    have := (key m hlt).2.2.1
    rw [hsnd] at this
    show compute_cost_1_2 I (mg.get_edge_cost m) (cache1_of s (mg.get m).1 i)
      (prepare_cache2 s i) = compute_cost I s (mg.get m).1 (mg.get m).2
    rw [cache2_of_customer s (mg.get m).1 hi0, hsnd]
    exact this
  · intro idx hin
    obtain ⟨hlt, hfst⟩ := hL.mem 0 idx hin
    have hj0 : (mg.get idx).2 ≠ 0 := fun e => hL.ne idx hlt (hfst.trans e.symm)
    have := (key idx hlt).2.2.1
    rw [hfst] at this
    show compute_cost_1_2 I (mg.get_edge_cost idx) (prepare_cache1_backup s 0 (mg.get idx).2)
      (prepare_cache2 s (mg.get idx).2) = compute_cost I s (mg.get idx).1 (mg.get idx).2
    rw [cache2_of_customer s 0 hj0, hfst]
    exact this
  · intro m hin
    obtain ⟨hlt, -, hsnd, -⟩ := CommonOperator.second_view hL hin
    have hj0 : (mg.get m).1 ≠ 0 := fun e => hL.ne m hlt (e.trans hsnd.symm)
    have := (key m hlt).2.2.1
    rw [hsnd] at this
    show compute_cost_1_2 I (mg.get_edge_cost m) (prepare_cache1 s (mg.get m).1)
      (prepare_cache2_backup s 0 (mg.get m).1) = compute_cost I s (mg.get m).1 (mg.get m).2
    rw [cache1_of_customer s 0 hj0, hsnd]
    exact this
  · intro idx hin
    obtain ⟨hlt, hfst⟩ := hL.mem 0 idx hin
    have hj0 : (mg.get idx).2 ≠ 0 := fun e => hL.ne idx hlt (hfst.trans e.symm)
    have htw := hL.twin_get idx hlt
    have := (key idx hlt).2.2.2
    rw [hfst] at this
    show compute_cost_pair I (mg.get_edge_cost idx) (prepare_cache12_backup s 0 (mg.get idx).2)
      (prepare_cache12 s (mg.get idx).2) =
      (compute_cost I s (mg.get idx).1 (mg.get idx).2, compute_cost I s (mg.get _).1 (mg.get _).2)
    rw [cache_of_customer s 0 hj0, htw, hfst]
    exact this

/-- The deltas that `asymmetric_init` computes for OneOneExchange are the values of
`compute_cost` on the solution, and the moves it evaluates are moves of the active list of
their first endpoint. -/
theorem operator_pair_exact (hsym : CostSym I) (hL : mg.Lists) (hc : mg.CostsOK I)
    (hR : Rep I s A) (hdep : ∀ r, A r ≠ [] → (0 : Int) ∈ A r)
    (hserved : ∀ idx, idx < mg.size →
      ((mg.get idx).1 ≠ 0 → (s.customers_list (mg.get idx).1).route_ptr ≠ 0) ∧
      ((mg.get idx).2 ≠ 0 → (s.customers_list (mg.get idx).2).route_ptr ≠ 0)) :
    CommonOperator.PairExact (operator I mg) mg s
      (fun m d => d = compute_cost I s (mg.get m).1 (mg.get m).2 ∧
        m ∈ mg.active_move_indices_involving_1st (mg.get m).1) := by
  have key : ∀ i idx, idx ∈ mg.active_move_indices_involving_1st i →
      compute_cost_pair I (mg.get_edge_cost idx) (cache_of s i (mg.get idx).2)
        (cache_of s (mg.get idx).2 i) =
        (compute_cost I s (mg.get idx).1 (mg.get idx).2,
          compute_cost I s (mg.get (MoveGenerators.get_twin_move_generator_index idx)).1
            (mg.get (MoveGenerators.get_twin_move_generator_index idx)).2) ∧
      idx ∈ mg.active_move_indices_involving_1st (mg.get idx).1 ∧
      MoveGenerators.get_twin_move_generator_index idx ∈
        mg.active_move_indices_involving_1st
          (mg.get (MoveGenerators.get_twin_move_generator_index idx)).1 := by
    intro i idx hin
    obtain ⟨hlt, hfst⟩ := hL.mem i idx hin
    obtain ⟨hne, h1, h2, he, -, htw⟩ := move_facts hsym hL hc hserved hlt
    have := (cached_cost_eq hsym hR hdep hne h1 h2).2
    rw [htw, he, ← hfst]
    exact ⟨this, hfst ▸ hin, hL.sym i idx hin⟩
  constructor
  · intro i idx hi0 hin
    obtain ⟨k1, k2, k3⟩ := key i idx hin
    have e : (operator I mg).compute_cost_pair idx ((operator I mg).prepare_cache12 s i)
        (if (mg.get idx).2 = 0 then (operator I mg).prepare_cache12_backup s (mg.get idx).2 i
          else (operator I mg).prepare_cache12 s (mg.get idx).2) =
        compute_cost_pair I (mg.get_edge_cost idx) (cache_of s i (mg.get idx).2)
          (cache_of s (mg.get idx).2 i) := by
      show compute_cost_pair I (mg.get_edge_cost idx) (prepare_cache12 s i)
        (cache_of s (mg.get idx).2 i) = _
      rw [cache_of_customer s (mg.get idx).2 hi0]
    rw [e, k1]
    exact ⟨⟨rfl, k2⟩, ⟨rfl, k3⟩⟩
  · intro idx hin
    obtain ⟨k1, k2, k3⟩ := key 0 idx hin
    obtain ⟨hlt, hfst⟩ := hL.mem 0 idx hin
    have hj0 : (mg.get idx).2 ≠ 0 := fun e => hL.ne idx hlt (hfst.trans e.symm)
    have e : (operator I mg).compute_cost_pair idx
        ((operator I mg).prepare_cache12_backup s 0 (mg.get idx).2)
        ((operator I mg).prepare_cache12 s (mg.get idx).2) =
        compute_cost_pair I (mg.get_edge_cost idx) (cache_of s 0 (mg.get idx).2)
          (cache_of s (mg.get idx).2 0) := by
      show compute_cost_pair I (mg.get_edge_cost idx)
        (prepare_cache12_backup s 0 (mg.get idx).2) (prepare_cache12 s (mg.get idx).2) = _
      rw [cache_of_customer s 0 hj0]
      rfl
    rw [e, k1]
    exact ⟨⟨rfl, k2⟩, ⟨rfl, k3⟩⟩

end Exact

end OneOneExchange
/-! ## The update bits and the affected vertices of a OneOneExchange move -/

theorem set_update_bit_true (bits : Int → Nat → Bool) (x : Int) (k0 : Nat) (v : Int) (k : Nat) :
    set_update_bit bits x k0 true v k = true ↔ (v = x ∧ k = k0) ∨ bits v k = true := by
  unfold set_update_bit upd
  by_cases c1 : v = x <;> by_cases c2 : k = k0 <;> simp [c1, c2]

namespace SparseIntSet

theorem insert_spec (st : SparseIntSet) (hok : st.OK) (x : Int) :
    (st.insert x).OK ∧ ∀ v, v ∈ (st.insert x).elements ↔ v = x ∨ v ∈ st.elements := by
  unfold insert contains
  by_cases c : st.flags x = true
  · rw [if_pos c]
    have hx := (hok x).1 c
    refine ⟨hok, fun v => ⟨fun h => Or.inr h, fun h => ?_⟩⟩
    rcases h with h | h
    · rw [h]
      exact hx
    · exact h
  · rw [if_neg c]
    unfold insert_without_checking_existance
    refine ⟨fun v => ?_, fun v => ?_⟩
    · show upd st.flags x true v = true ↔ v ∈ st.elements ++ [x]
      by_cases cv : v = x
      · rw [cv, upd_same]
        simp
      · rw [upd_other _ _ _ _ cv, hok v]
        simp [cv]
    · show v ∈ st.elements ++ [x] ↔ _
      simp [or_comm]

end SparseIntSet

namespace OneOneExchange

/-- The update bits after `execute`, none being set before: the first bit is set at the
vertices of `marked_first`, the second one at those of `marked_second`. -/
theorem mark_spec (s : Solution) (i j : Int) (bits : Int → Nat → Bool)
    (hb : ∀ v k, bits v k = false) (v : Int) (k : Nat) :
    mark s i j bits v k = true ↔
      (k = UPDATE_BITS_FIRST ∧ v ∈ marked_first s i j) ∨
      (k = UPDATE_BITS_SECOND ∧ v ∈ marked_second s i j) := by
  unfold mark marked_first marked_second
  simp only [set_update_bit_true, hb, List.mem_cons, List.mem_singleton, List.not_mem_nil]
  unfold UPDATE_BITS_FIRST UPDATE_BITS_SECOND
  obtain rfl | rfl | hk : k = 0 ∨ k = 1 ∨ (k ≠ 0 ∧ k ≠ 1) := by omega
  · simp
    tauto
  · simp
    tauto
  · simp [hk.1, hk.2]

/-- The set of the affected vertices after `execute`, started empty: its elements are the
vertices that carry an update bit. -/
theorem affected_spec (s : Solution) (i j : Int) (storage : SparseIntSet)
    (hs : storage.elements = [] ∧ ∀ v, storage.flags v = false) :
    (affected s i j storage).OK ∧
    ∀ v, v ∈ (affected s i j storage).get_elements ↔
      v ∈ marked_first s i j ∨ v ∈ marked_second s i j := by
  have h0 : storage.OK := fun v => by
    rw [hs.1, hs.2 v]
    simp
  unfold affected marked_first marked_second
  dsimp only
  obtain ⟨o1, m1⟩ := SparseIntSet.insert_spec _ h0
    (s.get_prev_vertex (s.get_route_index_fallback i j) i)
  obtain ⟨o2, m2⟩ := SparseIntSet.insert_spec _ o1 i
  obtain ⟨o3, m3⟩ := SparseIntSet.insert_spec _ o2
    (s.get_next_vertex (s.get_route_index_fallback i j) i)
  obtain ⟨o4, m4⟩ := SparseIntSet.insert_spec _ o3
    (s.get_next_vertex (s.get_route_index_fallback i j)
      (s.get_next_vertex (s.get_route_index_fallback i j) i))
  obtain ⟨o5, m5⟩ := SparseIntSet.insert_spec _ o4
    (s.get_prev_vertex (s.get_route_index_fallback j i)
      (s.get_prev_vertex (s.get_route_index_fallback j i) j))
  obtain ⟨o6, m6⟩ := SparseIntSet.insert_spec _ o5
    (s.get_prev_vertex (s.get_route_index_fallback j i) j)
  obtain ⟨o7, m7⟩ := SparseIntSet.insert_spec _ o6 j
  obtain ⟨o8, m8⟩ := SparseIntSet.insert_spec _ o7
    (s.get_next_vertex (s.get_route_index_fallback j i) j)
  refine ⟨o8, fun v => ?_⟩
  unfold SparseIntSet.get_elements
  rw [m8, m7, m6, m5, m4, m3, m2, m1, hs.1]
  simp only [List.mem_cons, List.mem_singleton, List.not_mem_nil, or_false]
  tauto

end OneOneExchange
/-! ## The local search cycle of OneOneExchange -/

namespace OneOneExchange

section Keeps

variable {I : Instance} {s : Solution} {A : Nat → List Int}

/-- A feasible move executed on a consistent solution whose routes serve a customer each:
besides what `execute_spec` states, every route of the new solution serves a customer and
the customers served stay served. -/
theorem execute_keeps (hR : Rep I s A) (hC : CostOK I s A)
    (hdep : ∀ r, A r ≠ [] → (0 : Int) ∈ A r) (hfull : ∀ r, A r ≠ [] → ∃ c ∈ A r, c ≠ 0)
    {i j : Int} (hij : i ≠ j) (hi : i ≠ 0 → (s.customers_list i).route_ptr ≠ 0)
    (hj : j ≠ 0 → (s.customers_list j).route_ptr ≠ 0)
    (hf : is_feasible I s i j = true) :
    ∃ B, Rep I (execute I s i j) B ∧ CostOK I (execute I s i j) B ∧
      (∀ r, B r ≠ [] → (0 : Int) ∈ B r) ∧ (∀ r, B r ≠ [] → ∃ c ∈ B r, c ≠ 0) ∧
      (∀ r, B r ~r
        (if r = s.get_route_index_fallback i j ∨ r = s.get_route_index_fallback j i then
          (A r).map (fun v =>
            if v = i then s.get_prev_vertex (s.get_route_index_fallback j i) j
            else if v = s.get_prev_vertex (s.get_route_index_fallback j i) j then i else v)
        else A r)) ∧
      (execute I s i j).solution_cost = s.solution_cost + compute_cost I s i j ∧
      (∀ v, v ≠ 0 → (s.customers_list v).route_ptr ≠ 0 →
        ((execute I s i j).customers_list v).route_ptr ≠ 0) := by
  obtain ⟨B, h1, h2, h3, h4, h5⟩ := execute_spec hR hC hdep hij hi hj hf
  obtain ⟨hiA, hjA⟩ := endpoints_mem hR hdep hij hi hj
  refine ⟨B, h1, h2, h3, ?_, h4, h5, ?_⟩
  · intro r hne
    have hlen : (B r).length = (A r).length := by
      have := (h4 r).perm.length_eq
      rw [this]
      by_cases c : r = s.get_route_index_fallback i j ∨ r = s.get_route_index_fallback j i
      · rw [if_pos c, List.length_map]
      · rw [if_neg c]
    have hA : A r ≠ [] := by
      intro e
      rw [e] at hlen
      exact hne (List.length_eq_zero.1 hlen)
    have h2len := two_le_length (hdep r hA) (hfull r hA)
    have hnd := (h1.routes r).nodup
    rw [← hlen] at h2len
    cases hB : B r with
    | nil => exact absurd hB hne
    | cons a t =>
      cases t with
      | nil =>
        rw [hB] at h2len
        simp at h2len
      | cons b t =>
        rw [hB] at hnd
        have hab : a ≠ b := fun e => by
          rw [e] at hnd
          exact (List.nodup_cons.1 hnd).1 (List.mem_cons_self _ _)
        by_cases c : a = 0
        · exact ⟨b, by simp, fun e => hab (c.trans e.symm)⟩
        · exact ⟨a, by simp, c⟩
  · intro v hv0 hv
    have hvA : v ∈ A (s.customers_list v).route_ptr := ((hR.routes _).mem_iff v hv0).2 ⟨rfl, hv⟩
    generalize hri : s.get_route_index_fallback i j = ri at *
    generalize hrj : s.get_route_index_fallback j i = rj at *
    have hpA : s.get_prev_vertex rj j ∈ A rj := (hR.nbrs hjA).2.1
    generalize hp : s.get_prev_vertex rj j = p at *
    generalize hr : (s.customers_list v).route_ptr = r at *
    have hin : ∃ r2, v ∈ B r2 := by
      by_cases c : r = ri ∨ r = rj
      · by_cases cvi : v = i
        · refine ⟨rj, (h4 rj).mem_iff.2 ?_⟩
          rw [if_pos (Or.inr rfl)]
          refine List.mem_map.2 ⟨p, hpA, ?_⟩
          by_cases cp : p = i
          · rw [if_pos cp, cp, cvi]
          · rw [if_neg cp, if_pos rfl, cvi]
        · by_cases cvp : v = p
          · refine ⟨ri, (h4 ri).mem_iff.2 ?_⟩
            rw [if_pos (Or.inl rfl)]
            refine List.mem_map.2 ⟨i, hiA, ?_⟩
            rw [if_pos rfl, cvp]
          · refine ⟨r, (h4 r).mem_iff.2 ?_⟩
            rw [if_pos c]
            refine List.mem_map.2 ⟨v, hvA, ?_⟩
            rw [if_neg cvi, if_neg cvp]
      · refine ⟨r, (h4 r).mem_iff.2 ?_⟩
        rw [if_neg c]
        exact hvA
    obtain ⟨r2, hr2⟩ := hin
    rw [(h1.route_of_mem hv0 hr2).1]
    exact (h1.route_of_mem hv0 hr2).2

end Keeps

section Cycle

variable {I : Instance} {mg : MoveGenerators}

/-- A feasible move of the heap is executed and the deltas are updated: the statements
return, the state is again a state of the cycle, and the cost of the solution has changed
by the delta stored for the move. -/
theorem cycle_step (hsym : CostSym I) (hL : mg.Lists) (hc : mg.CostsOK I) {tolerance : Int}
    {s : Solution} {st : CommonOperator} (hI : CycleInv I mg tolerance s st) (m : Nat)
    (hm : st.heap.heap_index m ≠ -1)
    (hf : is_feasible I s (mg.get m).1 (mg.get m).2 = true) :
    ∃ r, CommonOperator.apply_move (operator I mg) mg tolerance false s st m = some r ∧
      CycleInv I mg tolerance r.1 r.2 ∧
      r.1.solution_cost = s.solution_cost + st.heap.delta m := by
  obtain ⟨A, hR, hC, hdep, hfull⟩ := hI.rep
  obtain ⟨hlt, hact⟩ := hI.act m hm
  have hne := hL.ne m hlt
  obtain ⟨hs1, hs2⟩ := hI.served m hlt
  obtain ⟨B, b1, b2, b3, b4, b5, b6, b7⟩ := execute_keeps hR hC hdep hfull hne hs1 hs2 hf
  have served2 : ∀ idx, idx < mg.size →
      ((mg.get idx).1 ≠ 0 →
        ((execute I s (mg.get m).1 (mg.get m).2).customers_list (mg.get idx).1).route_ptr ≠ 0) ∧
      ((mg.get idx).2 ≠ 0 →
        ((execute I s (mg.get m).1 (mg.get m).2).customers_list (mg.get idx).2).route_ptr ≠ 0) :=
    fun idx h => ⟨fun h0 => b7 _ h0 ((hI.served idx h).1 h0),
      fun h0 => b7 _ h0 ((hI.served idx h).2 h0)⟩
  have hX := operator_upd_exact hsym hL hc b1 b3 served2
  obtain ⟨aOK, aMem⟩ := affected_spec s (mg.get m).1 (mg.get m).2 st.affected_vertices
    hI.no_affected
  have hmark := mark_spec s (mg.get m).1 (mg.get m).2 st.update_bits hI.bits
  obtain ⟨st2, e, r1, r2, r3, r4, r5, r6, r7⟩ := CommonOperator.asymmetric_update_ok hL hX
    { st with
      affected_vertices := affected s (mg.get m).1 (mg.get m).2 st.affected_vertices
      update_bits := mark s (mg.get m).1 (mg.get m).2 st.update_bits }
    hI.heap_ok hI.act hI.low
    (fun x hx hF hS => by
      show st.heap.delta x = _
      rw [hI.val x hx]
      obtain ⟨xlt, -⟩ := hI.act x hx
      refine (compute_cost_local hR hdep hfull hne hs1 hs2 hf b1 b3 b4 b5 (hL.ne x xlt)
        (hI.served x xlt).1 (hI.served x xlt).2 ?_ ?_).symm
      · intro hin
        have h1 : mark s (mg.get m).1 (mg.get m).2 st.update_bits (mg.get x).1
            UPDATE_BITS_FIRST = false := hF
        rw [(hmark _ _).2 (Or.inl ⟨rfl, hin⟩)] at h1
        cases h1
      · intro hin
        have h1 : mark s (mg.get m).1 (mg.get m).2 st.update_bits (mg.get x).2
            UPDATE_BITS_SECOND = false := hS
        rw [(hmark _ _).2 (Or.inr ⟨rfl, hin⟩)] at h1
        cases h1)
    hI.stamps
    (fun v hv => by
      show mark s (mg.get m).1 (mg.get m).2 st.update_bits v UPDATE_BITS_FIRST = true ∨
        mark s (mg.get m).1 (mg.get m).2 st.update_bits v UPDATE_BITS_SECOND = true
      rcases (aMem v).1 hv with h | h
      · exact Or.inl ((hmark _ _).2 (Or.inl ⟨rfl, h⟩))
      · exact Or.inr ((hmark _ _).2 (Or.inr ⟨rfl, h⟩)))
    (fun v k hk => by
      have hk2 : mark s (mg.get m).1 (mg.get m).2 st.update_bits v k = true := hk
      rcases (hmark v k).1 hk2 with ⟨h1, h2⟩ | ⟨h1, h2⟩
      · exact ⟨(aMem v).2 (Or.inl h2), Or.inl h1⟩
      · exact ⟨(aMem v).2 (Or.inr h2), Or.inr h1⟩)
  have e2 : CommonOperator.descriptors_update (operator I mg) mg tolerance false
      (execute I s (mg.get m).1 (mg.get m).2)
      { st with
        affected_vertices := affected s (mg.get m).1 (mg.get m).2 st.affected_vertices
        update_bits := mark s (mg.get m).1 (mg.get m).2 st.update_bits } = some st2 := by
    unfold CommonOperator.descriptors_update
    rw [if_neg (by show ¬ (false = true); decide)]
    exact e
  refine ⟨(execute I s (mg.get m).1 (mg.get m).2,
    { st2 with affected_vertices := st2.affected_vertices.clear }), ?_, ?_, ?_⟩
  · exact congrArg (Option.map (fun x : CommonOperator =>
      (execute I s (mg.get m).1 (mg.get m).2,
        { x with affected_vertices := x.affected_vertices.clear }))) e2
  · have r7b : st2.affected_vertices =
        affected s (mg.get m).1 (mg.get m).2 st.affected_vertices := r7
    obtain ⟨c1, c2, -⟩ := SparseIntSet.clear_spec (r7b ▸ aOK)
    exact ⟨⟨B, b1, b2, b3, b4⟩, served2, r1, r2, r3, r4, r5, r6, c2, c1⟩
  · show (execute I s (mg.get m).1 (mg.get m).2).solution_cost = _
    rw [b6, hI.val m hm]

/-- The initialization of a cycle of OneOneExchange returns and leaves a state of the
cycle. -/
theorem cycle_init (hsym : CostSym I) (hL : mg.Lists) (hc : mg.CostsOK I) (tolerance : Int)
    {s : Solution} {A : Nat → List Int} (hR : Rep I s A) (hC : CostOK I s A)
    (hdep : ∀ r, A r ≠ [] → (0 : Int) ∈ A r) (hfull : ∀ r, A r ≠ [] → ∃ c ∈ A r, c ≠ 0)
    (hserved : ∀ idx, idx < mg.size →
      ((mg.get idx).1 ≠ 0 → (s.customers_list (mg.get idx).1).route_ptr ≠ 0) ∧
      ((mg.get idx).2 ≠ 0 → (s.customers_list (mg.get idx).2).route_ptr ≠ 0))
    (svc : List Int) (hsvc : s.cache.Holds svc) (fuel : Nat) (hfuel : svc.length < fuel)
    (st : CommonOperator) (hok : st.heap.OK) (hts : ∀ v, st.vertex_timestamp v ≤ st.timegen)
    (hbits : ∀ v k, st.update_bits v k = false)
    (haff : st.affected_vertices.elements = [] ∧ ∀ v, st.affected_vertices.flags v = false) :
    ∃ st1, CommonOperator.initialize_descriptors (operator I mg) mg tolerance false s fuel
        st.start = some st1 ∧ CycleInv I mg tolerance s st1 := by
  obtain ⟨k1, -, k3⟩ := MGHeap.reset_ok st.heap hok
  obtain ⟨st1, e, hI, t1, -, u1, a1⟩ := CommonOperator.asymmetric_init_ok (operator I mg) hL
    tolerance false s (operator_pair_exact hsym hL hc hR hdep hserved) svc hsvc fuel hfuel
    st.start k1 k3 hts rfl rfl
  have hev : ∀ m, st1.heap.heap_index m ≠ -1 → m ∈ st1.evaluated := by
    intro m hm
    by_contra h
    exact hm (hI.unheaped m h)
  refine ⟨st1, ?_, ⟨A, hR, hC, hdep, hfull⟩, hserved, hI.heap_ok, ?_, ?_, ?_, t1, ?_, ?_⟩
  · unfold CommonOperator.initialize_descriptors
    rw [if_neg (by show ¬ (false = true); decide)]
    exact e
  · intro m hm
    exact ⟨hI.in_range m (hev m hm), (hI.vals m (hev m hm)).2⟩
  · intro m hm
    exact le_of_lt (hI.lows m hm)
  · intro m hm
    exact (hI.vals m (hev m hm)).1
  · intro v k
    rw [u1]
    exact hbits v k
  · rw [a1]
    exact haff

/-- Every state of a cycle of OneOneExchange in which the deltas are checked is a state of
the cycle. -/
theorem checked_inv (hsym : CostSym I) (hL : mg.Lists) (hc : mg.CostsOK I) {tolerance : Int}
    {s0 : Solution} {A : Nat → List Int} (hR : Rep I s0 A) (hC : CostOK I s0 A)
    (hdep : ∀ r, A r ≠ [] → (0 : Int) ∈ A r) (hfull : ∀ r, A r ≠ [] → ∃ c ∈ A r, c ≠ 0)
    (hserved : ∀ idx, idx < mg.size →
      ((mg.get idx).1 ≠ 0 → (s0.customers_list (mg.get idx).1).route_ptr ≠ 0) ∧
      ((mg.get idx).2 ≠ 0 → (s0.customers_list (mg.get idx).2).route_ptr ≠ 0))
    (svc : List Int) (hsvc : s0.cache.Holds svc) (fuel : Nat) (hfuel : svc.length < fuel)
    (st0 : CommonOperator) (hok : st0.heap.OK)
    (hts : ∀ v, st0.vertex_timestamp v ≤ st0.timegen)
    (hbits : ∀ v k, st0.update_bits v k = false)
    (haff : st0.affected_vertices.elements = [] ∧ ∀ v, st0.affected_vertices.flags v = false)
    {s : Solution} {st : CommonOperator}
    (h : CommonOperator.Checked (operator I mg) mg tolerance false fuel s0 st0 s st) :
    CycleInv I mg tolerance s st := by
  induction h with
  | init st1 e =>
    obtain ⟨st2, e2, hI⟩ := cycle_init hsym hL hc tolerance hR hC hdep hfull
      hserved svc hsvc fuel hfuel st0 hok hts hbits haff
    have e3 : CommonOperator.initialize_descriptors (operator I mg) mg tolerance false s0 fuel
        st0.start = some st1 := e
    rw [e2] at e3
    rw [← Option.some.inj e3]
    exact hI
  | step s st index r _ hnext happ ih =>
    unfold CommonOperator.next_move at hnext
    have hfound := List.find?_some hnext
    have hmem := List.mem_of_find?_eq_some hnext
    have hidx : index < st.heap.size := List.mem_range.1 hmem
    have hfeas : is_feasible I s (mg.get (st.heap.heap index)).1
        (mg.get (st.heap.heap index)).2 = true := by
      simpa using hfound
    have hheaped : st.heap.heap_index (st.heap.heap index) ≠ -1 := by
      rw [ih.heap_ok.linked.idx index hidx]
      omega
    obtain ⟨r2, e2, hI2, -⟩ := cycle_step hsym hL hc ih _ hheaped hfeas
    rw [e2] at happ
    rw [← Option.some.inj happ]
    exact hI2

end Cycle

end OneOneExchange
/-! ## The path example -/

theorem pathInstance_sym : CostSym pathInstance :=
  ⟨fun i j => abs_sub_comm i j, fun i => by show |i - i| = 0; simp⟩

theorem pathOne_rep : Rep pathInstance pathOne pathOneA ∧ CostOK pathInstance pathOne pathOneA :=
  ⟨build_rep true pathInstance_sym (fresh_rep pathInstance 5) (by decide) (by decide)
    (by decide),
   build_costOK true pathInstance_sym (fresh_rep pathInstance 5) (fresh_costOK pathInstance 5)
     (by decide)⟩

theorem pathTwo_rep : Rep pathInstance pathTwo pathTwoA ∧ CostOK pathInstance pathTwo pathTwoA :=
  ⟨insert_vertex_rep true pathOne_rep.1 (by decide) (by decide) (by decide) (by decide),
   insert_vertex_costOK true pathOne_rep.1 pathOne_rep.2 (by decide) (by decide)⟩

theorem pathThree_rep :
    Rep pathInstance pathThree pathThreeA ∧ CostOK pathInstance pathThree pathThreeA :=
  ⟨build_rep true pathInstance_sym pathTwo_rep.1 (by decide) (by decide) (by decide),
   build_costOK true pathInstance_sym pathTwo_rep.1 pathTwo_rep.2 (by decide)⟩

theorem pathSol_rep : Rep pathInstance pathSol pathSolA ∧ CostOK pathInstance pathSol pathSolA :=
  ⟨build_rep true pathInstance_sym pathThree_rep.1 (by decide) (by decide) (by decide),
   build_costOK true pathInstance_sym pathThree_rep.1 pathThree_rep.2 (by decide)⟩

theorem pathSolA_cases (r : Nat) :
    pathSolA r = [] ∨ pathSolA r = [2, 0, 1] ∨ pathSolA r = [0, 3] ∨ pathSolA r = [0, 4] := by
  unfold pathSolA pathThreeA pathTwoA pathOneA upd
  by_cases c3 : r = 3
  · simp [c3]
  · by_cases c2 : r = 2
    · simp [c2]
    · by_cases c1 : r = 1
      · simp [c1]
      · simp [c1, c2, c3]

theorem pathSol_depot : ∀ r, pathSolA r ≠ [] → (0 : Int) ∈ pathSolA r := by
  intro r hr
  rcases pathSolA_cases r with h | h | h | h
  · exact absurd h hr
  · rw [h]; decide
  · rw [h]; decide
  · rw [h]; decide

theorem pathSol_full : ∀ r, pathSolA r ≠ [] → ∃ c ∈ pathSolA r, c ≠ 0 := by
  intro r hr
  rcases pathSolA_cases r with h | h | h | h
  · exact absurd h hr
  · rw [h]; exact ⟨2, by decide, by decide⟩
  · rw [h]; exact ⟨3, by decide, by decide⟩
  · rw [h]; exact ⟨4, by decide, by decide⟩

/-- The cache of `pathSol` holds the vertices 4, 3, 0 and 1. -/
theorem pathSol_cache : pathSol.cache.Holds [4, 3, 0, 1] := by
  have c0 : (Solution.fresh pathInstance 5).cache = LRUCache.create 5 :=
    (Solution.fresh_fields pathInstance 5).2.2.2.2.2.1
  have c1 : pathOne.cache = (LRUCache.create (5 : Nat)).insert 1 := by
    have h := (Solution.build_scalars pathInstance (Solution.fresh pathInstance 5) true
      1).2.2.2.2.2.2
    rw [c0] at h
    exact h
  have c2 : pathTwo.cache = (pathOne.cache.insert 1).insert 0 :=
    Solution.insert_vertex_cache pathInstance pathOne true 1 0 2
  have c3 : pathThree.cache = pathTwo.cache.insert 3 :=
    (Solution.build_scalars pathInstance pathTwo true 3).2.2.2.2.2.2
  have c4 : pathSol.cache = pathThree.cache.insert 4 :=
    (Solution.build_scalars pathInstance pathThree true 4).2.2.2.2.2.2
  obtain ⟨h1, s1⟩ := LRUCache.insert_holds (LRUCache.create (5 : Nat)) 5 [] 1
    (LRUCache.create_holds 5) rfl (by decide) (by decide)
  obtain ⟨h2, s2⟩ := LRUCache.insert_holds _ 5 _ 1 h1 s1 (by decide) (by decide)
  obtain ⟨h3, s3⟩ := LRUCache.insert_holds _ 5 _ 0 h2 s2 (by decide) (by decide)
  obtain ⟨h4, s4⟩ := LRUCache.insert_holds _ 5 _ 3 h3 s3 (by decide) (by decide)
  obtain ⟨h5, -⟩ := LRUCache.insert_holds _ 5 _ 4 h4 s4 (by decide) (by decide)
  rw [c4, c3, c2, c1]
  exact h5

theorem pathMG_lists : pathMG.Lists := by
  have hsz : pathMG.size = 4 := rfl
  have hlist : ∀ v idx, idx ∈ pathMG.active_move_indices_involving_1st v →
      (v = 2 ∧ idx = 0) ∨ (v = 2 ∧ idx = 2) ∨ (v = 3 ∧ idx = 1) ∨ (v = 4 ∧ idx = 3) := by
    intro v idx h
    have h2 : idx ∈ (if v = 2 then [0, 2] else if v = 3 then [1] else if v = 4 then [3]
      else ([] : List Nat)) := h
    by_cases c1 : v = 2
    · rw [if_pos c1] at h2
      simp at h2
      rcases h2 with e | e
      · exact Or.inl ⟨c1, e⟩
      · exact Or.inr (Or.inl ⟨c1, e⟩)
    · rw [if_neg c1] at h2
      by_cases c2 : v = 3
      · rw [if_pos c2] at h2
        exact Or.inr (Or.inr (Or.inl ⟨c2, by simpa using h2⟩))
      · rw [if_neg c2] at h2
        by_cases c3 : v = 4
        · rw [if_pos c3] at h2
          exact Or.inr (Or.inr (Or.inr ⟨c3, by simpa using h2⟩))
        · rw [if_neg c3] at h2
          exact absurd h2 (List.not_mem_nil _)
  refine ⟨fun idx h => ?_, fun idx h => ?_, fun idx h => ?_, fun v idx h => ?_, fun v => ?_,
    fun v idx h => ?_⟩
  · rw [hsz] at h
    interval_cases idx <;> decide
  · rw [hsz] at h ⊢
    interval_cases idx <;> decide
  · rw [hsz] at h
    interval_cases idx <;> decide
  · rcases hlist v idx h with ⟨e1, e2⟩ | ⟨e1, e2⟩ | ⟨e1, e2⟩ | ⟨e1, e2⟩ <;> subst e1 <;>
      subst e2 <;> exact ⟨by decide, by decide⟩
  · show (if v = 2 then [0, 2] else if v = 3 then [1] else if v = 4 then [3]
      else ([] : List Nat)).Nodup
    split_ifs <;> simp
  · rcases hlist v idx h with ⟨e1, e2⟩ | ⟨e1, e2⟩ | ⟨e1, e2⟩ | ⟨e1, e2⟩ <;> subst e1 <;>
      subst e2 <;> decide

theorem pathMG_costs : pathMG.CostsOK pathInstance := by
  refine ⟨by decide, fun m a b h => ?_⟩
  have h2 : [((2 : Int), (3 : Int)), (3, 2), (2, 4), (4, 2)][2 * m]? = some (a, b) := h
  show [(1 : Int), 2][m]? = some (pathInstance.cost a b)
  rcases m with _ | _ | m
  · simp at h2
    obtain ⟨rfl, rfl⟩ := h2
    decide
  · simp at h2
    obtain ⟨rfl, rfl⟩ := h2
    decide
  · have : 2 * (m + 1 + 1) = (2 * m) + 4 := by ring
    rw [this] at h2
    simp at h2

theorem pathSol_served : ∀ idx, idx < pathMG.size →
    ((pathMG.get idx).1 ≠ 0 → (pathSol.customers_list (pathMG.get idx).1).route_ptr ≠ 0) ∧
    ((pathMG.get idx).2 ≠ 0 → (pathSol.customers_list (pathMG.get idx).2).route_ptr ≠ 0) := by
  intro idx h
  have hsz : pathMG.size = 4 := rfl
  rw [hsz] at h
  interval_cases idx <;> decide
/-- The cycle of OneOneExchange with a tolerance above 0: a local search cycle
(`handle_partial_solutions` off) on a consistent solution every route of which serves a
customer and which serves the customers of the move generators, with symmetric arc costs, a
registry with the properties `Lists` whose edge costs are the arc costs, and started with a
consistent heap, no update bit set and no affected vertex: the initialization returns, and
in every state in which the cycle checks the deltas, that is after the initialization and
after every executed move followed by the update, every move generator in the heap,
feasible or not, has the delta `compute_cost(solution, move)` of the current solution, so
that `__check_deltas` holds; and when the scan of the heap finds a move, its execution and
the update return and the cost of the solution is strictly smaller than before. -/
theorem oneone_cycle_exact (I : Instance) (mg : MoveGenerators) (hsym : CostSym I)
    (hL : mg.Lists) (hc : mg.CostsOK I) (tolerance : Int) (htol : 0 < tolerance)
    (s0 : Solution) (A : Nat → List Int) (hR : Rep I s0 A) (hC : CostOK I s0 A)
    (hdep : ∀ r, A r ≠ [] → (0 : Int) ∈ A r) (hfull : ∀ r, A r ≠ [] → ∃ c ∈ A r, c ≠ 0)
    (hserved : ∀ idx, idx < mg.size →
      ((mg.get idx).1 ≠ 0 → (s0.customers_list (mg.get idx).1).route_ptr ≠ 0) ∧
      ((mg.get idx).2 ≠ 0 → (s0.customers_list (mg.get idx).2).route_ptr ≠ 0))
    (svc : List Int) (hsvc : s0.cache.Holds svc) (fuel : Nat) (hfuel : svc.length < fuel)
    (st0 : CommonOperator) (hok : st0.heap.OK)
    (hts : ∀ v, st0.vertex_timestamp v ≤ st0.timegen)
    (hbits : ∀ v k, st0.update_bits v k = false)
    (haff : st0.affected_vertices.elements = [] ∧
      ∀ v, st0.affected_vertices.flags v = false) :
    (∃ st1, CommonOperator.initialize_descriptors (OneOneExchange.operator I mg) mg tolerance
      false s0 fuel st0.start = some st1) ∧
    ∀ s st, CommonOperator.Checked (OneOneExchange.operator I mg) mg tolerance false fuel s0
        st0 s st →
      (∀ index, index < st.heap.size →
        st.heap.delta (st.heap.heap index) =
          OneOneExchange.compute_cost I s (mg.get (st.heap.heap index)).1
            (mg.get (st.heap.heap index)).2) ∧
      CommonOperator.check_deltas (OneOneExchange.operator I mg) s st = true ∧
      ∀ index, CommonOperator.next_move (OneOneExchange.operator I mg) mg false s st =
          some index →
        ∃ r, CommonOperator.apply_move (OneOneExchange.operator I mg) mg tolerance false s st
            (st.heap.heap index) = some r ∧
          r.1.get_cost < s.get_cost := by
  constructor
  · obtain ⟨st1, e, -⟩ := OneOneExchange.cycle_init hsym hL hc tolerance hR hC
      hdep hfull hserved svc hsvc fuel hfuel st0 hok hts hbits haff
    exact ⟨st1, e⟩
  · intro s st hch
    have hI := OneOneExchange.checked_inv hsym hL hc hR hC hdep hfull hserved svc hsvc fuel
      hfuel st0 hok hts hbits haff hch
    have hheaped : ∀ index, index < st.heap.size →
        st.heap.heap_index (st.heap.heap index) ≠ -1 := by
      intro index hidx
      rw [hI.heap_ok.linked.idx index hidx]
      omega
    have hval : ∀ index, index < st.heap.size →
        st.heap.delta (st.heap.heap index) =
          OneOneExchange.compute_cost I s (mg.get (st.heap.heap index)).1
            (mg.get (st.heap.heap index)).2 :=
      fun index hidx => hI.val _ (hheaped index hidx)
    refine ⟨hval, ?_, ?_⟩
    · unfold CommonOperator.check_deltas
      rw [List.all_eq_true]
      intro index hin
      have hidx : index < st.heap.size := List.mem_range.1 hin
      dsimp only
      split_ifs
      · rfl
      · exact decide_eq_true (hval index hidx)
    · intro index hnext
      unfold CommonOperator.next_move at hnext
      have hfound := List.find?_some hnext
      have hidx : index < st.heap.size := List.mem_range.1 (List.mem_of_find?_eq_some hnext)
      have hfeas : OneOneExchange.is_feasible I s (mg.get (st.heap.heap index)).1
          (mg.get (st.heap.heap index)).2 = true := by
        simpa using hfound
      obtain ⟨r, e, -, hcost⟩ := OneOneExchange.cycle_step hsym hL hc hI _
        (hheaped index hidx) hfeas
      refine ⟨r, e, ?_⟩
      have hlow := hI.low _ (hheaped index hidx)
      show r.1.solution_cost < s.solution_cost
      rw [hcost]
      omega

theorem oneone_cycle_exact_witness :
    CostSym pathInstance ∧ pathMG.Lists ∧ pathMG.CostsOK pathInstance ∧ (0 : Int) < 1 ∧
    Rep pathInstance pathSol pathSolA ∧ CostOK pathInstance pathSol pathSolA ∧
    pathSol.cache.Holds [4, 3, 0, 1] ∧ [(4 : Int), 3, 0, 1].length < 5 ∧
    idleOperator.heap.OK ∧
    ((∃ st1, CommonOperator.initialize_descriptors (OneOneExchange.operator pathInstance pathMG)
      pathMG 1 false pathSol 5 idleOperator.start = some st1) ∧
    ∀ s st, CommonOperator.Checked (OneOneExchange.operator pathInstance pathMG) pathMG 1 false
        5 pathSol idleOperator s st →
      (∀ index, index < st.heap.size →
        st.heap.delta (st.heap.heap index) =
          OneOneExchange.compute_cost pathInstance s (pathMG.get (st.heap.heap index)).1
            (pathMG.get (st.heap.heap index)).2) ∧
      CommonOperator.check_deltas (OneOneExchange.operator pathInstance pathMG) s st = true ∧
      ∀ index, CommonOperator.next_move (OneOneExchange.operator pathInstance pathMG) pathMG
          false s st = some index →
        ∃ r, CommonOperator.apply_move (OneOneExchange.operator pathInstance pathMG) pathMG 1
            false s st (st.heap.heap index) = some r ∧
          r.1.get_cost < s.get_cost) :=
  ⟨pathInstance_sym, pathMG_lists, pathMG_costs, by decide, pathSol_rep.1, pathSol_rep.2,
    pathSol_cache, by decide, MGHeap.empty_ok _,
    oneone_cycle_exact pathInstance pathMG pathInstance_sym pathMG_lists pathMG_costs 1
      (by decide) pathSol pathSolA pathSol_rep.1 pathSol_rep.2 pathSol_depot pathSol_full
      pathSol_served [4, 3, 0, 1] pathSol_cache 5 (by decide) idleOperator (MGHeap.empty_ok _)
      (fun _ => Nat.le_refl _) (fun _ _ => rfl) ⟨rfl, fun _ => rfl⟩⟩

/-- C35 (code defect): the claim fails on the code. With the tolerance 0, on the solution
`pathSol` (routes `depot, 1, 2`, `depot, 3` and `depot, 4` on a line, consistent, started
from the idle state) and the registry `pathMG`, the cycle executes the move `(3, 2)` and
its update recomputes the delta of the move `(4, 2)` as 0. The initialization admits a move
to the heap only with `delta < -tolerance`, but the update tests `delta > -tolerance`
before it removes one, so the move with the delta `0 = -tolerance` stays in the heap, at
position 3. In the state reached `__check_deltas` holds, the scan of the driver finds this
feasible move, and its execution leaves the cost of the solution at 16: the executed move
does not decrease the cost, and the assertion `old_cost > solution.get_cost()` of the
driver fails. -/
theorem oneone_cycle_zero_tolerance :
    CommonOperator.Checked (OneOneExchange.operator pathInstance pathMG) pathMG 0 false 5
      pathSol idleOperator (pathNext 0).1 (pathNext 0).2 ∧
    CommonOperator.check_deltas (OneOneExchange.operator pathInstance pathMG) (pathNext 0).1
      (pathNext 0).2 = true ∧
    CommonOperator.next_move (OneOneExchange.operator pathInstance pathMG) pathMG false
      (pathNext 0).1 (pathNext 0).2 = some 3 ∧
    pathMG.get ((pathNext 0).2.heap.heap 3) = (4, 2) ∧
    (pathNext 0).2.heap.delta ((pathNext 0).2.heap.heap 3) = 0 ∧
    (pathNext 0).1.get_cost = 16 ∧
    ∃ r, CommonOperator.apply_move (OneOneExchange.operator pathInstance pathMG) pathMG 0 false
        (pathNext 0).1 (pathNext 0).2 ((pathNext 0).2.heap.heap 3) = some r ∧
      r.1.get_cost = 16 := by
  have h1 : CommonOperator.initialize_descriptors (OneOneExchange.operator pathInstance pathMG)
      pathMG 0 false pathSol 5 idleOperator.start = some (pathInit 0) :=
    some_getD_of_isSome (by decide)
  have h2 : CommonOperator.next_move (OneOneExchange.operator pathInstance pathMG) pathMG false
      pathSol (pathInit 0) = some 2 := by decide
  have h3 : (pathInit 0).heap.heap 2 = 1 := by decide
  have h4 : CommonOperator.apply_move (OneOneExchange.operator pathInstance pathMG) pathMG 0
      false pathSol (pathInit 0) ((pathInit 0).heap.heap 2) = some (pathNext 0) := by
    rw [h3]
    exact some_getD_of_isSome (by decide)
  refine ⟨CommonOperator.Checked.step pathSol (pathInit 0) 2 (pathNext 0)
    (CommonOperator.Checked.init (pathInit 0) h1) h2 h4, by decide, by decide, by decide,
    by decide, by decide, ?_⟩
  exact ⟨_, some_getD_of_isSome (d := (pathSol, idleOperator)) (by decide), by decide⟩
theorem pow2_eq (e : Int) : pow2 e = (2 : ℚ) ^ e := by
  unfold pow2
  split_ifs with h
  · have : e = (e.toNat : Int) := (Int.toNat_of_nonneg h).symm
    conv_rhs => rw [this]
    rw [zpow_natCast]
    push_cast
    rfl
  · have h2 : e = - ((-e).toNat : Int) := by
      rw [Int.toNat_of_nonneg (by omega)]
      omega
    conv_rhs => rw [h2]
    rw [zpow_neg, zpow_natCast]
    push_cast
    rw [one_div]

theorem pow2_pos (e : Int) : 0 < pow2 e := by
  rw [pow2_eq]
  positivity

theorem pow2_add (a b : Int) : pow2 (a + b) = pow2 a * pow2 b := by
  rw [pow2_eq, pow2_eq, pow2_eq, zpow_add₀ (by norm_num)]

theorem pow2_le {a b : Int} (h : a ≤ b) : pow2 a ≤ pow2 b := by
  rw [pow2_eq, pow2_eq]
  exact zpow_le_zpow_right₀ (by norm_num) h

theorem pow2_nat (n : Nat) : pow2 (n : Int) = ((2 ^ n : Nat) : ℚ) := by
  rw [pow2_eq, zpow_natCast]
  push_cast
  rfl

theorem log2_fuel_spec : ∀ (f n : Nat), n ≤ f → 0 < n →
    2 ^ log2_fuel f n ≤ n ∧ n < 2 ^ (log2_fuel f n + 1)
  | 0, n, h, h0 => by omega
  | f + 1, n, h, h0 => by
    unfold log2_fuel
    split_ifs with c
    · constructor <;> simp <;> omega
    · obtain ⟨a, b⟩ := log2_fuel_spec f (n / 2) (by omega) (by omega)
      rw [pow_succ, pow_succ]
      rw [pow_succ] at b
      constructor <;> omega

theorem log2_spec (n : Nat) (h : 0 < n) : 2 ^ log2 n ≤ n ∧ n < 2 ^ (log2 n + 1) :=
  log2_fuel_spec n n (le_refl _) h

/-- The exponent of a positive number locates it between two powers of 2. -/
theorem exponent_spec {a : ℚ} (h : 0 < a) :
    pow2 (exponent a) ≤ a ∧ a < pow2 (exponent a + 1) := by
  have hn : 0 < a.num := Rat.num_pos.2 h
  have hd : 0 < a.den := a.den_pos
  obtain ⟨n1, n2⟩ := log2_spec a.num.natAbs (by omega)
  obtain ⟨d1, d2⟩ := log2_spec a.den hd
  have ha : a = (a.num.natAbs : ℚ) / (a.den : ℚ) := by
    have e : ((a.num.natAbs : Nat) : ℚ) = (a.num : ℚ) := by
      rw [Nat.cast_natAbs, abs_of_pos hn]
    rw [e]
    exact (Rat.num_div_den a).symm
  have hdq : (0 : ℚ) < (a.den : ℚ) := by exact_mod_cast hd
  have N1 : pow2 (log2 a.num.natAbs : Int) ≤ (a.num.natAbs : ℚ) := by
    rw [pow2_nat]; exact_mod_cast n1
  have N2 : (a.num.natAbs : ℚ) < pow2 ((log2 a.num.natAbs : Int) + 1) := by
    have := pow2_nat (log2 a.num.natAbs + 1)
    push_cast at this
    rw [this]; exact_mod_cast n2
  have D1 : pow2 (log2 a.den : Int) ≤ (a.den : ℚ) := by
    rw [pow2_nat]; exact_mod_cast d1
  have D2 : (a.den : ℚ) < pow2 ((log2 a.den : Int) + 1) := by
    have := pow2_nat (log2 a.den + 1)
    push_cast at this
    rw [this]; exact_mod_cast d2
  unfold exponent
  generalize (log2 a.num.natAbs : Int) = A at N1 N2 ⊢
  generalize (log2 a.den : Int) = B at D1 D2 ⊢
  have up : a < pow2 (A - B + 1) := by
    have e : pow2 (A + 1) = pow2 (A - B + 1) * pow2 B := by rw [← pow2_add]; congr 1; ring
    rw [ha, div_lt_iff₀ hdq]
    calc (a.num.natAbs : ℚ) < pow2 (A + 1) := N2
      _ = pow2 (A - B + 1) * pow2 B := e
      _ ≤ pow2 (A - B + 1) * (a.den : ℚ) :=
        mul_le_mul_of_nonneg_left D1 (le_of_lt (pow2_pos _))
  have lo : pow2 (A - B - 1) ≤ a := by
    have e : pow2 A = pow2 (A - B - 1) * pow2 (B + 1) := by rw [← pow2_add]; congr 1; ring
    rw [ha, le_div_iff₀ hdq]
    calc pow2 (A - B - 1) * (a.den : ℚ) ≤ pow2 (A - B - 1) * pow2 (B + 1) :=
        mul_le_mul_of_nonneg_left (le_of_lt D2) (le_of_lt (pow2_pos _))
      _ = pow2 A := e.symm
      _ ≤ (a.num.natAbs : ℚ) := N1
  split_ifs with c
  · exact ⟨c, up⟩
  · refine ⟨lo, ?_⟩
    have e : A - B - 1 + 1 = A - B := by ring
    rw [e]
    exact not_le.1 c

theorem exponent_mono {a b : ℚ} (h : 0 < a) (hab : a ≤ b) : exponent a ≤ exponent b := by
  obtain ⟨s1, _⟩ := exponent_spec h
  obtain ⟨_, t2⟩ := exponent_spec (lt_of_lt_of_le h hab)
  by_contra c
  have := pow2_le (show exponent b + 1 ≤ exponent a by omega)
  exact absurd (lt_of_le_of_lt (le_trans this (le_trans s1 hab)) t2) (lt_irrefl _)

theorem round_even_bounds (t : ℚ) : ⌊t⌋ ≤ round_even t ∧ round_even t ≤ ⌊t⌋ + 1 := by
  unfold round_even
  split_ifs <;> constructor <;> omega

theorem round_even_int (z : Int) : round_even (z : ℚ) = z := by
  unfold round_even
  rw [Int.floor_intCast, sub_self, if_pos (by norm_num)]

theorem round_even_mono {s t : ℚ} (h : s ≤ t) : round_even s ≤ round_even t := by
  have hf : ⌊s⌋ ≤ ⌊t⌋ := Int.floor_le_floor h
  rcases lt_or_eq_of_le hf with c | c
  · have a := (round_even_bounds s).2
    have b := (round_even_bounds t).1
    omega
  · unfold round_even
    rw [c]
    have hst : s - ⌊t⌋ ≤ t - ⌊t⌋ := by linarith
    split_ifs <;> first | omega | (exfalso; linarith)

theorem round_even_ge {z : Int} {t : ℚ} (h : (z : ℚ) ≤ t) : z ≤ round_even t := by
  have := round_even_mono h
  rwa [round_even_int] at this

theorem round_even_le {z : Int} {t : ℚ} (h : t ≤ (z : ℚ)) : round_even t ≤ z := by
  have := round_even_mono h
  rwa [round_even_int] at this

theorem round_even_neg (t : ℚ) : round_even (-t) = - round_even t := by
  by_cases hi : t = ⌊t⌋
  · rw [hi, ← Int.cast_neg, round_even_int, round_even_int]
  · have h1 : (⌊t⌋ : ℚ) < t := lt_of_le_of_ne (Int.floor_le t) (Ne.symm hi)
    have h2 : t < ⌊t⌋ + 1 := Int.lt_floor_add_one t
    have hf : ⌊-t⌋ = -⌊t⌋ - 1 := by
      rw [Int.floor_eq_iff]
      push_cast
      constructor <;> linarith
    unfold round_even
    rw [hf]
    push_cast
    have e1 : -t - (-(⌊t⌋ : ℚ) - 1) = 1 - (t - ⌊t⌋) := by ring
    rw [e1]
    split_ifs <;> first | omega | (exfalso; linarith)
theorem quantum_pos (x : ℚ) : 0 < quantum x := pow2_pos _

theorem quantum_neg (x : ℚ) : quantum (-x) = quantum x := by
  unfold quantum
  rw [abs_neg]

theorem binary64_zero : binary64 0 = 0 := by
  unfold binary64
  rw [if_pos rfl]

/-- Rounding commutes with the change of sign. -/
theorem binary64_neg (x : ℚ) : binary64 (-x) = - binary64 x := by
  unfold binary64
  by_cases h : x = 0
  · subst h
    simp
  · rw [if_neg h, if_neg (neg_ne_zero.2 h), quantum_neg, neg_div, round_even_neg]
    push_cast
    ring

theorem binary64_nonneg {x : ℚ} (h : 0 ≤ x) : 0 ≤ binary64 x := by
  unfold binary64
  split_ifs
  · exact le_refl _
  · refine mul_nonneg ?_ (le_of_lt (quantum_pos x))
    have : (0 : Int) ≤ round_even (x / quantum x) :=
      round_even_ge (by
        push_cast
        exact div_nonneg h (le_of_lt (quantum_pos x)))
    exact_mod_cast this

theorem binary64_nonpos {x : ℚ} (h : x ≤ 0) : binary64 x ≤ 0 := by
  have := binary64_nonneg (show 0 ≤ -x by linarith)
  rw [binary64_neg] at this
  linarith

/-- The rounding of a positive number stays below the next power of 2. -/
theorem binary64_le_pow2 {x : ℚ} (hx : 0 < x) :
    binary64 x ≤ pow2 (max (exponent x) (-1022) + 1) := by
  obtain ⟨_, s2⟩ := exponent_spec hx
  unfold binary64 quantum
  rw [if_neg (ne_of_gt hx), abs_of_pos hx]
  have hE : exponent x ≤ max (exponent x) (-1022) := le_max_left _ _
  generalize max (exponent x) (-1022) = E at hE ⊢
  have hq := pow2_pos (E - 52)
  have h1 : x / pow2 (E - 52) ≤ ((2 ^ 53 : Int) : ℚ) := by
    rw [div_le_iff₀ hq]
    have e : ((2 ^ 53 : Int) : ℚ) * pow2 (E - 52) = pow2 (E + 1) := by
      have : ((2 ^ 53 : Int) : ℚ) = pow2 53 := by
        rw [pow2_eq]
        norm_num
      rw [this, ← pow2_add]
      congr 1
      ring
    rw [e]
    exact le_trans (le_of_lt s2) (pow2_le (by omega))
  have h2 := round_even_le h1
  have e : pow2 (E + 1) = ((2 ^ 53 : Int) : ℚ) * pow2 (E - 52) := by
    have : ((2 ^ 53 : Int) : ℚ) = pow2 53 := by
      rw [pow2_eq]
      norm_num
    rw [this, ← pow2_add]
    congr 1
    ring
  rw [e]
  exact mul_le_mul_of_nonneg_right (by exact_mod_cast h2) (le_of_lt hq)

/-- The rounding of a positive number in the normal range stays above the power of 2
below it. -/
theorem pow2_le_binary64 {x : ℚ} (hx : 0 < x) (hn : -1022 ≤ exponent x) :
    pow2 (exponent x) ≤ binary64 x := by
  obtain ⟨s1, _⟩ := exponent_spec hx
  unfold binary64 quantum
  rw [if_neg (ne_of_gt hx), abs_of_pos hx, max_eq_left hn]
  generalize exponent x = E at *
  have hq := pow2_pos (E - 52)
  have e : pow2 E = ((2 ^ 52 : Int) : ℚ) * pow2 (E - 52) := by
    have : ((2 ^ 52 : Int) : ℚ) = pow2 52 := by
      rw [pow2_eq]
      norm_num
    rw [this, ← pow2_add]
    congr 1
    ring
  have h1 : ((2 ^ 52 : Int) : ℚ) ≤ x / pow2 (E - 52) := by
    rw [le_div_iff₀ hq, ← e]
    exact s1
  have h2 := round_even_ge h1
  rw [e]
  exact mul_le_mul_of_nonneg_right (by exact_mod_cast h2) (le_of_lt hq)

theorem binary64_mono_pos {x y : ℚ} (hx : 0 < x) (hxy : x ≤ y) : binary64 x ≤ binary64 y := by
  have hy : 0 < y := lt_of_lt_of_le hx hxy
  have hex := exponent_mono hx hxy
  by_cases c : max (exponent x) (-1022) = max (exponent y) (-1022)
  · unfold binary64 quantum
    rw [if_neg (ne_of_gt hx), if_neg (ne_of_gt hy), abs_of_pos hx, abs_of_pos hy, c]
    have hq := pow2_pos (max (exponent y) (-1022) - 52)
    refine mul_le_mul_of_nonneg_right ?_ (le_of_lt hq)
    have : round_even (x / pow2 (max (exponent y) (-1022) - 52)) ≤
        round_even (y / pow2 (max (exponent y) (-1022) - 52)) :=
      round_even_mono (div_le_div_of_nonneg_right hxy (le_of_lt hq))
    exact_mod_cast this
  · have hlt : max (exponent x) (-1022) < exponent y := by
      rcases le_total (exponent y) (-1022) with d | d
      · exfalso
        apply c
        rw [max_eq_right d, max_eq_right (le_trans hex d)]
      · by_contra hc
        apply c
        have h1 : exponent y ≤ max (exponent x) (-1022) := by omega
        rcases le_total (exponent x) (-1022) with f | f
        · rw [max_eq_right f] at h1 ⊢
          rw [max_eq_right h1]
        · rw [max_eq_left f] at h1 ⊢
          rw [max_eq_left d]
          omega
    have hn : -1022 ≤ exponent y := by
      have := le_max_right (exponent x) (-1022)
      omega
    calc binary64 x ≤ pow2 (max (exponent x) (-1022) + 1) := binary64_le_pow2 hx
      _ ≤ pow2 (exponent y) := pow2_le (by omega)
      _ ≤ binary64 y := pow2_le_binary64 hy hn

/-- Rounding is monotone. -/
theorem binary64_mono {x y : ℚ} (h : x ≤ y) : binary64 x ≤ binary64 y := by
  rcases lt_or_le 0 x with hx | hx
  · exact binary64_mono_pos hx h
  · rcases le_or_lt 0 y with hy | hy
    · exact le_trans (binary64_nonpos hx) (binary64_nonneg hy)
    · have := binary64_mono_pos (show 0 < -y by linarith) (show -y ≤ -x by linarith)
      rw [binary64_neg, binary64_neg] at this
      linarith

theorem exponent_dyadic {m : Int} {k : Int} (h1 : 1 ≤ |m|) (h2 : |m| < 2 ^ 53) :
    k ≤ exponent (|(m : ℚ) * pow2 k|) ∧ exponent (|(m : ℚ) * pow2 k|) ≤ k + 52 := by
  have hp := pow2_pos k
  have habs : |(m : ℚ) * pow2 k| = (|m| : ℚ) * pow2 k := by
    rw [abs_mul, abs_of_pos hp]
  have hm1 : (1 : ℚ) ≤ |(m : ℚ)| := by exact_mod_cast h1
  have hm2 : |(m : ℚ)| < pow2 53 := by
    rw [pow2_eq]
    have : ((|m| : Int) : ℚ) < ((2 ^ 53 : Int) : ℚ) := by exact_mod_cast h2
    push_cast at this
    exact_mod_cast this
  have hpos : 0 < |(m : ℚ) * pow2 k| := by
    rw [habs]
    exact mul_pos (by linarith) hp
  obtain ⟨s1, s2⟩ := exponent_spec hpos
  rw [habs] at s1 s2 ⊢
  generalize exponent (|(m : ℚ)| * pow2 k) = e at s1 s2 ⊢
  constructor
  · by_contra c
    have := pow2_le (show e + 1 ≤ k by omega)
    have : |(m : ℚ)| * pow2 k < pow2 k := lt_of_lt_of_le s2 this
    nlinarith
  · by_contra c
    have h3 := pow2_le (show k + 53 ≤ e by omega)
    rw [add_comm, pow2_add] at h3
    have : pow2 53 * pow2 k ≤ |(m : ℚ)| * pow2 k := le_trans h3 s1
    have := le_of_mul_le_mul_right this hp
    linarith

/-- A number `m * 2 ^ k` with an integer `m` of fewer than 54 binary digits and
`k >= -1074` is a value of type `double`: rounding leaves it as it is. -/
theorem binary64_dyadic (m k : Int) (hm : |m| < 2 ^ 53) (hk : -1074 ≤ k) :
    binary64 ((m : ℚ) * pow2 k) = (m : ℚ) * pow2 k := by
  by_cases m0 : m = 0
  · subst m0
    simp [binary64_zero]
  have h1 : 1 ≤ |m| := by
    have := abs_pos.2 m0
    omega
  obtain ⟨e1, e2⟩ := exponent_dyadic (k := k) h1 hm
  have hx : (m : ℚ) * pow2 k ≠ 0 :=
    mul_ne_zero (by exact_mod_cast m0) (ne_of_gt (pow2_pos k))
  unfold binary64 quantum
  rw [if_neg hx]
  generalize exponent (|(m : ℚ) * pow2 k|) = e at e1 e2 ⊢
  have hE : max e (-1022) - 52 ≤ k := by
    rcases le_total e (-1022) with c | c
    · rw [max_eq_right c]; omega
    · rw [max_eq_left c]; omega
  generalize max e (-1022) - 52 = E at hE ⊢
  have hsplit : pow2 k = pow2 (k - E) * pow2 E := by
    rw [← pow2_add]
    congr 1
    ring
  have hnat : pow2 (k - E) = (((2 : Int) ^ (k - E).toNat : Int) : ℚ) := by
    have : k - E = ((k - E).toNat : Int) := (Int.toNat_of_nonneg (by omega)).symm
    conv_lhs => rw [this]
    rw [pow2_nat]
    push_cast
    rfl
  have hq := pow2_pos E
  have hdiv : (m : ℚ) * pow2 k / pow2 E = ((m * (2 : Int) ^ (k - E).toNat : Int) : ℚ) := by
    rw [hsplit, hnat]
    push_cast
    field_simp
    ring
  rw [hdiv, round_even_int, hsplit, hnat]
  push_cast
  ring

/-- A whole number of at most `2 ^ 53` in absolute value is a value of type `double`. -/
theorem binary64_int (z : Int) (h : |z| ≤ 2 ^ 53) : binary64 (z : ℚ) = (z : ℚ) := by
  rcases lt_or_eq_of_le h with c | c
  · have := binary64_dyadic z 0 c (by norm_num)
    have e : pow2 0 = 1 := by rw [pow2_eq]; norm_num
    rwa [e, mul_one] at this
  · have hz : z = 2 ^ 53 ∨ z = -(2 ^ 53) := by
      rcases abs_cases z with ⟨a, _⟩ | ⟨a, _⟩ <;> omega
    have e : pow2 53 = ((2 ^ 53 : Int) : ℚ) := by rw [pow2_eq]; norm_num
    rcases hz with rfl | rfl
    · have := binary64_dyadic 1 53 (by norm_num) (by norm_num)
      rw [e] at this
      simpa using this
    · have := binary64_dyadic (-1) 53 (by norm_num) (by norm_num)
      rw [e] at this
      simpa using this

/-- Rounding is the identity on the values of type `double`, so a bound that is such a
value survives the rounding. -/
theorem binary64_le_of_le {x d : ℚ} (hd : binary64 d = d) (h : x ≤ d) : binary64 x ≤ d := by
  rw [← hd]
  exact binary64_mono h

theorem binary64_ge_of_ge {x d : ℚ} (hd : binary64 d = d) (h : d ≤ x) : d ≤ binary64 x := by
  rw [← hd]
  exact binary64_mono h
theorem fadd_mono_left {a b : ℚ} (c : ℚ) (h : a ≤ b) : fadd a c ≤ fadd b c :=
  binary64_mono (by linarith)

theorem fsub_mono_left {a b : ℚ} (c : ℚ) (h : a ≤ b) : fsub a c ≤ fsub b c :=
  binary64_mono (by linarith)

theorem fmul_nonneg {a b : ℚ} (ha : 0 ≤ a) (hb : 0 ≤ b) : 0 ≤ fmul a b :=
  binary64_nonneg (mul_nonneg ha hb)

theorem fadd_zero_zero : fadd 0 0 = 0 := by
  unfold fadd
  rw [add_zero, binary64_zero]
/-! ## The checks of the constructor of Params -/

namespace Params

theorem foldl_range_succ {α : Type} (f : α → Nat → α) (a : α) (n : Nat) :
    (List.range (n + 1)).foldl f a = f ((List.range n).foldl f a) n := by
  rw [List.range_succ, List.foldl_append]
  rfl

/-- The loop over the clients leaves in `maxDemand` the largest of 0 and the demands. -/
theorem demand_loop_spec (demands : List ℚ) : ∀ n, n ≤ demands.length →
    0 ≤ ((List.range n).foldl (demand_step demands) (0, Dbl.fin 0)).1 ∧
    (∀ d ∈ demands.take n, d ≤ ((List.range n).foldl (demand_step demands) (0, Dbl.fin 0)).1) ∧
    (((List.range n).foldl (demand_step demands) (0, Dbl.fin 0)).1 = 0 ∨
      ((List.range n).foldl (demand_step demands) (0, Dbl.fin 0)).1 ∈ demands.take n) := by
  intro n
  induction n with
  | zero => intro _; simp
  | succ n ih =>
    intro hn
    obtain ⟨a2, a3, a4⟩ := ih (by omega)
    have hlt : n < demands.length := by omega
    have hget : demands.getD n 0 = demands[n] := by
      rw [List.getD_eq_getElem?_getD, List.getElem?_eq_getElem hlt]
      rfl
    have htake : demands.take (n + 1) = demands.take n ++ [demands[n]] := by
      rw [List.take_succ, List.getElem?_eq_getElem hlt]
      rfl
    rw [foldl_range_succ, htake]
    generalize (List.range n).foldl (demand_step demands) (0, Dbl.fin 0) = X at a2 a3 a4 ⊢
    unfold demand_step
    rw [hget]
    dsimp only
    refine ⟨?_, ?_, ?_⟩
    · split_ifs with c
      · exact le_of_lt (lt_of_le_of_lt a2 c)
      · exact a2
    · intro d hd
      rcases List.mem_append.1 hd with h | h
      · have := a3 d h
        split_ifs with c
        · exact le_of_lt (lt_of_le_of_lt this c)
        · exact this
      · rw [List.mem_singleton.1 h]
        split_ifs with c
        · exact le_refl _
        · exact not_lt.1 c
    · split_ifs with c
      · right
        exact List.mem_append.2 (Or.inr (List.mem_singleton.2 rfl))
      · rcases a4 with h | h
        · exact Or.inl h
        · exact Or.inr (List.mem_append.2 (Or.inl h))

/-- The inner loop of the calculation of the maximum distance. -/
theorem dist_row_spec (d : Nat → Nat → ℚ) (i : Nat) (m : ℚ) : ∀ n,
    m ≤ (List.range n).foldl (dist_step d i) m ∧
    (∀ j, j < n → d i j ≤ (List.range n).foldl (dist_step d i) m) ∧
    ((List.range n).foldl (dist_step d i) m = m ∨
      ∃ j, j < n ∧ d i j = (List.range n).foldl (dist_step d i) m) := by
  intro n
  induction n with
  | zero => simp
  | succ n ih =>
    obtain ⟨a1, a2, a3⟩ := ih
    rw [foldl_range_succ]
    generalize (List.range n).foldl (dist_step d i) m = X at a1 a2 a3 ⊢
    unfold dist_step
    refine ⟨?_, fun j hj => ?_, ?_⟩
    · split_ifs with c
      · exact le_of_lt (lt_of_le_of_lt a1 c)
      · exact a1
    · rcases Nat.lt_succ_iff_lt_or_eq.1 hj with h | h
      · have := a2 j h
        split_ifs with c
        · exact le_of_lt (lt_of_le_of_lt this c)
        · exact this
      · rw [h]
        split_ifs with c
        · exact le_refl _
        · exact not_lt.1 c
    · split_ifs with c
      · exact Or.inr ⟨n, Nat.lt_succ_self n, rfl⟩
      · rcases a3 with h | ⟨j, hj, e⟩
        · exact Or.inl h
        · exact Or.inr ⟨j, Nat.lt_succ_of_lt hj, e⟩

/-- The calculation of the maximum distance leaves the largest of 0 and the entries. -/
theorem max_dist_rows (d : Nat → Nat → ℚ) (w : Nat) : ∀ n,
    0 ≤ (List.range n).foldl (fun m i => (List.range w).foldl (dist_step d i) m) 0 ∧
    (∀ i j, i < n → j < w →
      d i j ≤ (List.range n).foldl (fun m i => (List.range w).foldl (dist_step d i) m) 0) ∧
    ((List.range n).foldl (fun m i => (List.range w).foldl (dist_step d i) m) 0 = 0 ∨
      ∃ i j, i < n ∧ j < w ∧
        d i j = (List.range n).foldl (fun m i => (List.range w).foldl (dist_step d i) m) 0) := by
  intro n
  induction n with
  | zero => simp
  | succ n ih =>
    obtain ⟨a1, a2, a3⟩ := ih
    rw [foldl_range_succ]
    obtain ⟨b1, b2, b3⟩ := dist_row_spec d n
      ((List.range n).foldl (fun m i => (List.range w).foldl (dist_step d i) m) 0) w
    refine ⟨le_trans a1 b1, fun i j hi hj => ?_, ?_⟩
    · rcases Nat.lt_succ_iff_lt_or_eq.1 hi with h | h
      · exact le_trans (a2 i j h hj) b1
      · rw [h]
        exact b2 j hj
    · rcases b3 with h | ⟨j, hj, e⟩
      · rw [h]
        rcases a3 with h2 | ⟨i, j, hi, hj, e⟩
        · exact Or.inl h2
        · exact Or.inr ⟨i, j, Nat.lt_succ_of_lt hi, hj, e⟩
      · exact Or.inr ⟨n, j, Nat.lt_succ_self n, hj, e⟩

theorem tenth_value : binary64 (1 / 10) = 3602879701896397 / 36028797018963968 := by
  decide!

/-- A value of type `double` is below the literal `0.1` exactly when it is below the
number `1/10`. -/
theorem lt_tenth_iff {m : ℚ} (hm : binary64 m = m) : m < binary64 (1 / 10) ↔ m < 1 / 10 := by
  constructor
  · intro h
    by_contra c
    have := binary64_mono (not_lt.1 c)
    rw [hm] at this
    exact absurd h (not_lt.2 this)
  · intro h
    rw [tenth_value]
    refine lt_trans h ?_
    norm_num

/-- A largest value and the largest of 0 and the values lie outside `[0.1, 100000]`
together. -/
theorem outside_iff {m M : ℚ} (hm : binary64 m = m) (hle : M ≤ m)
    (hor : m = 0 ∨ m ≤ M) :
    (m < binary64 (1 / 10) ∨ m > 100000) ↔ (M < 1 / 10 ∨ 100000 < M) := by
  rw [lt_tenth_iff hm]
  constructor
  · rintro (h | h)
    · exact Or.inl (lt_of_le_of_lt hle h)
    · rcases hor with e | e
      · rw [e] at h
        exact absurd h (by norm_num)
      · exact Or.inr (lt_of_lt_of_le h e)
  · rintro (h | h)
    · rcases hor with e | e
      · rw [e]
        exact Or.inl (by norm_num)
      · exact Or.inl (lt_of_le_of_lt e h)
    · exact Or.inr (lt_of_lt_of_le h hle)

end Params
/-! ## Claim C31 -/

/-- C31: the constructor of `Params` throws if and only if the largest entry `M` of the
distance matrix lies outside `[0.1, 100000]`, or the largest demand `D` lies outside
`[0.1, 100000]`, or the fleet size in force `F` (the given one, or
`(int)ceil(1.3 * totalDemand / vehicleCapacity) + 3` when none is given) is smaller than
`ceil(totalDemand / vehicleCapacity)`. The data are values of type `double`, the vector of
demands holds at least the depot, and the matrix is read at the indices of the vertices.
The sum `totalDemand`, the product and the quotients are those of the arithmetic of
`double` (a zero capacity gives an infinity or NaN), and the fleet size in force is
defined: when none is given, the default is in the range of `int`, outside of which the
conversion is undefined. -/
theorem params_throws_iff (dist_mtx : Nat → Nat → ℚ) (demands : List ℚ)
    (vehicleCapacity : ℚ) (nbVeh : Int) (hne : demands ≠ [])
    (hdist : ∀ i j, i < demands.length → j < demands.length →
      binary64 (dist_mtx i j) = dist_mtx i j)
    (hdem : ∀ d ∈ demands, binary64 d = d) {M D : ℚ}
    (hM : (∀ i j, i < demands.length → j < demands.length → dist_mtx i j ≤ M) ∧
      ∃ i j, i < demands.length ∧ j < demands.length ∧ dist_mtx i j = M)
    (hD : (∀ d ∈ demands, d ≤ D) ∧ D ∈ demands) (F : Int)
    (hF : Params.fleet demands vehicleCapacity nbVeh = some F) :
    (∃ b, Params.throws dist_mtx demands vehicleCapacity nbVeh = some b) ∧
    (Params.throws dist_mtx demands vehicleCapacity nbVeh = some true ↔
      ((M < 1 / 10 ∨ 100000 < M) ∨ (D < 1 / 10 ∨ 100000 < D) ∨
        Dbl.lt (Dbl.fin (F : ℚ)) (Params.needed demands vehicleCapacity) = true)) := by
  have hlen : 0 < demands.length := List.length_pos.2 hne
  have hn : (((demands.length : Int) - 1 + 1).toNat) = demands.length := by omega
  obtain ⟨a2, a3, a4⟩ := Params.demand_loop_spec demands demands.length (le_refl _)
  rw [List.take_length] at a3 a4
  obtain ⟨b1, b2, b3⟩ := Params.max_dist_rows dist_mtx demands.length demands.length
  have hmd : binary64 ((List.range demands.length).foldl
      (fun m i => (List.range demands.length).foldl (Params.dist_step dist_mtx i) m) 0) =
      (List.range demands.length).foldl
      (fun m i => (List.range demands.length).foldl (Params.dist_step dist_mtx i) m) 0 := by
    rcases b3 with h | ⟨i, j, hi, hj, e⟩
    · rw [h, binary64_zero]
    · rw [← e]
      exact hdist i j hi hj
  have hmq : binary64 ((List.range demands.length).foldl (Params.demand_step demands)
      (0, Dbl.fin 0)).1 =
      ((List.range demands.length).foldl (Params.demand_step demands) (0, Dbl.fin 0)).1 := by
    rcases a4 with h | h
    · rw [h, binary64_zero]
    · exact hdem _ h
  have hdist2 := Params.outside_iff (M := M) hmd
    (by obtain ⟨i, j, hi, hj, e⟩ := hM.2; rw [← e]; exact b2 i j hi hj)
    (by
      rcases b3 with h | ⟨i, j, hi, hj, e⟩
      · exact Or.inl h
      · exact Or.inr (by rw [← e]; exact hM.1 i j hi hj))
  have hdem2 := Params.outside_iff (M := D) hmq (a3 D hD.2)
    (by
      rcases a4 with h | h
      · exact Or.inl h
      · exact Or.inr (hD.1 _ h))
  have hF2 : (if nbVeh = 2147483647 then
      Params.default_fleet (Params.demand_loop demands).2 vehicleCapacity else some nbVeh) =
      some F := hF
  unfold Params.throws Params.construct Params.max_dist Params.needed
  dsimp only
  rw [hF2]
  dsimp only
  unfold Params.demand_loop
  rw [hn]
  by_cases c1 : (List.range demands.length).foldl
      (fun m i => (List.range demands.length).foldl (Params.dist_step dist_mtx i) m) 0 <
        binary64 (1 / 10) ∨
      (List.range demands.length).foldl
      (fun m i => (List.range demands.length).foldl (Params.dist_step dist_mtx i) m) 0 > 100000
  · rw [if_pos c1]
    exact ⟨⟨_, rfl⟩, fun _ => Or.inl (hdist2.1 c1), fun _ => rfl⟩
  rw [if_neg c1]
  have n1 : ¬ (M < 1 / 10 ∨ 100000 < M) := fun h => c1 (hdist2.2 h)
  by_cases c2 : ((List.range demands.length).foldl (Params.demand_step demands)
      (0, Dbl.fin 0)).1 < binary64 (1 / 10) ∨
      ((List.range demands.length).foldl (Params.demand_step demands) (0, Dbl.fin 0)).1 > 100000
  · rw [if_pos c2]
    exact ⟨⟨_, rfl⟩, fun _ => Or.inr (Or.inl (hdem2.1 c2)), fun _ => rfl⟩
  rw [if_neg c2]
  have n2 : ¬ (D < 1 / 10 ∨ 100000 < D) := fun h => c2 (hdem2.2 h)
  by_cases c3 : Dbl.lt (Dbl.fin (F : ℚ)) (Dbl.ceil (Dbl.div
      ((List.range demands.length).foldl (Params.demand_step demands) (0, Dbl.fin 0)).2
      (Dbl.fin vehicleCapacity))) = true
  · rw [if_pos c3]
    exact ⟨⟨_, rfl⟩, fun _ => Or.inr (Or.inr c3), fun _ => rfl⟩
  · rw [if_neg c3]
    refine ⟨⟨_, rfl⟩, fun h => absurd h (by simp), fun h => ?_⟩
    rcases h with h | h | h
    · exact absurd h n1
    · exact absurd h n2
    · exact absurd h c3

theorem params_throws_iff_witness :
    Params.fleet [0, 3, 4] 10 1 = some 1 ∧
    ((∃ b, Params.throws (fun i j => if i = j then 0 else 5) [0, 3, 4] 10 1 = some b) ∧
    (Params.throws (fun i j => if i = j then 0 else 5) [0, 3, 4] 10 1 = some true ↔
      (((5 : ℚ) < 1 / 10 ∨ 100000 < (5 : ℚ)) ∨ ((4 : ℚ) < 1 / 10 ∨ 100000 < (4 : ℚ)) ∨
        Dbl.lt (Dbl.fin ((1 : Int) : ℚ)) (Params.needed [0, 3, 4] 10) = true))) :=
  ⟨rfl, params_throws_iff (fun i j => if i = j then 0 else 5) [0, 3, 4] 10 1 (by simp)
    (fun i j _ _ => by
      show binary64 (if i = j then (0 : ℚ) else 5) = if i = j then (0 : ℚ) else 5
      split_ifs
      · exact binary64_zero
      · exact binary64_int 5 (by norm_num))
    (fun d hd => by
      simp only [List.mem_cons, List.mem_singleton, List.not_mem_nil, or_false] at hd
      rcases hd with h | h | h <;> rw [h]
      · exact binary64_zero
      · exact binary64_int 3 (by norm_num)
      · exact binary64_int 4 (by norm_num))
    ⟨fun i j _ _ => by
      show (if i = j then (0 : ℚ) else 5) ≤ 5
      split_ifs <;> norm_num, 0, 1, by decide, by decide, by norm_num⟩
    ⟨fun d hd => by
      simp only [List.mem_cons, List.mem_singleton, List.not_mem_nil, or_false] at hd
      rcases hd with h | h | h <;> rw [h] <;> norm_num, by simp⟩
    1 rfl⟩

/-- The checks of the constructor at the capacity 0: with the demands 3 and 4 and a given
fleet of one vehicle the quotient `totalDemand / vehicleCapacity` is the positive infinity
and the constructor throws; with no fleet given the conversion `(int)` of the infinity is
undefined. With the capacity `3/7` (rounded) and the total demand 3 the quotient rounds to
7, so that seven vehicles pass the check; with the capacity 10 and no fleet given the
default is `ceil(1.3 * 7 / 10) + 3 = 4`. -/
theorem params_zero_capacity :
    Params.throws (fun i j => if i = j then 0 else 5) [0, 3, 4] 0 1 = some true ∧
    Params.needed [0, 3, 4] 0 = Dbl.pinf ∧
    Params.throws (fun i j => if i = j then 0 else 5) [0, 3, 4] 0 2147483647 = none ∧
    Params.fleet [0, 3, 4] 10 2147483647 = some 4 ∧
    Params.throws (fun i j => if i = j then 0 else 5) [0, 3, 4] 10 2147483647 = some false ∧
    Params.needed [0, 1, 2] (binary64 (3 / 7)) = Dbl.fin 7 ∧
    (7 : ℚ) < 3 / binary64 (3 / 7) := by
  refine ⟨by decide!, by decide!, by decide!, by decide!, by decide!, by decide!, by decide!⟩
namespace Split

theorem upd2_same {α : Type} (m : Nat → Nat → α) (k j : Nat) (v : α) : upd2 m k j v k j = v := by
  simp [upd2, upd]

theorem upd2_other {α : Type} (m : Nat → Nat → α) (k j : Nat) (v : α) (a b : Nat)
    (h : ¬ (a = k ∧ b = j)) : upd2 m k j v a b = m a b := by
  unfold upd2 upd
  by_cases e1 : a = k
  · subst e1
    have : b ≠ j := fun e => h ⟨rfl, e⟩
    simp [this]
  · simp [e1]

/-- The fields left by one iteration of the first loop of `generalSplit`. -/
theorem prepare_step_fields (p : Params) (T : List Int) (sp : Split) (i : Nat) (hi : 1 ≤ i) :
    (prepare_step p T sp i).cliSplit = upd sp.cliSplit i (client p T i) ∧
    (prepare_step p T sp i).sumLoad = upd sp.sumLoad i (fadd (sp.sumLoad (i - 1)) (p.demand (cust T i))) ∧
    (prepare_step p T sp i).sumService =
      upd sp.sumService i (fadd (sp.sumService (i - 1)) (p.serviceDuration (cust T i))) ∧
    (prepare_step p T sp i).sumDistance =
      upd sp.sumDistance i (fadd (sp.sumDistance (i - 1)) (sp.cliSplit (i - 1)).dnext) ∧
    (prepare_step p T sp i).potential = sp.potential ∧
    (prepare_step p T sp i).pred = sp.pred ∧
    (prepare_step p T sp i).maxVehicles = sp.maxVehicles := by
  have hne : i - 1 ≠ i := by omega
  have e1 : cust T (i + 1) = T.getD i 0 := by simp [cust]
  refine ⟨?_, ?_, ?_, ?_, rfl, rfl, rfl⟩
  · simp only [prepare_step, client, cust, e1]
    simp
  · simp [prepare_step, upd, cust]
  · simp [prepare_step, upd, cust]
  · simp [prepare_step, upd, hne]

theorem prepare_fold (p : Params) (T : List Int) (sp : Split) (hb : Base sp) : ∀ n : Nat,
    n ≤ p.nbClients →
    let s := (List.range n).foldl (fun (s : Split) (m : Nat) => prepare_step p T s (m + 1)) sp
    (∀ i, 1 ≤ i → i ≤ n → s.cliSplit i = client p T i) ∧
    (∀ i, i ≤ n → s.sumLoad i = loadTo p T i) ∧
    (∀ i, i ≤ n → s.sumService i = servTo p T i) ∧
    (∀ i, i ≤ n → s.sumDistance i = distTo p T i) ∧
    s.cliSplit 0 = sp.cliSplit 0 ∧
    s.potential = sp.potential ∧ s.pred = sp.pred ∧ s.maxVehicles = sp.maxVehicles := by
  intro n
  induction n with
  | zero =>
    intro _
    simp only [List.range_zero, List.foldl_nil]
    refine ⟨fun i h1 h2 => by omega, fun i h => ?_, fun i h => ?_, fun i h => ?_, trivial,
      trivial, trivial, trivial⟩
    · have : i = 0 := by omega
      subst this; exact hb.load0
    · have : i = 0 := by omega
      subst this; exact hb.serv0
    · have : i = 0 := by omega
      subst this; exact hb.dist0
  | succ n ih =>
    intro hn
    obtain ⟨c1, c2, c3, c4, c5, c6, c7, c8⟩ := ih (by omega)
    simp only [List.range_succ, List.foldl_append, List.foldl_cons, List.foldl_nil]
    obtain ⟨f1, f2, f3, f4, f5, f6, f7⟩ := prepare_step_fields p T
      ((List.range n).foldl (fun (s : Split) (m : Nat) => prepare_step p T s (m + 1)) sp)
      (n + 1) (by omega)
    rw [f1, f2, f3, f4, f5, f6, f7]
    refine ⟨fun i h1 h2 => ?_, fun i h => ?_, fun i h => ?_, fun i h => ?_, ?_, c6, c7, c8⟩
    · by_cases e : i = n + 1
      · rw [e, upd_same]
      · rw [upd_other _ _ _ _ e]; exact c1 i h1 (by omega)
    · by_cases e : i = n + 1
      · rw [e, upd_same]
        simp only [Nat.add_sub_cancel]
        rw [c2 n (le_refl _)]
        rfl
      · rw [upd_other _ _ _ _ e]; exact c2 i (by omega)
    · by_cases e : i = n + 1
      · rw [e, upd_same]
        simp only [Nat.add_sub_cancel]
        rw [c3 n (le_refl _)]
        rfl
      · rw [upd_other _ _ _ _ e]; exact c3 i (by omega)
    · by_cases e : i = n + 1
      · rw [e, upd_same]
        simp only [Nat.add_sub_cancel]
        rw [c4 n (le_refl _)]
        show _ = fadd (distTo p T n) (if n = 0 then 0 else (client p T n).dnext)
        by_cases e0 : n = 0
        · subst e0
          rw [if_pos rfl, c5, hb.dnext0]
        · rw [if_neg e0, c1 n (by omega) (le_refl _)]
      · rw [upd_other _ _ _ _ e]; exact c4 i (by omega)
    · rw [upd_other _ _ _ _ (by omega)]
      exact c5

/-- The first loop of `generalSplit` fills the vectors with the quantities of the tour and
keeps the potentials and predecessors. -/
theorem prepare_spec (p : Params) (T : List Int) (sp : Split) (hb : Base sp) :
    Prepared p T (prepare p T sp) ∧ Base (prepare p T sp) ∧
    (prepare p T sp).potential = sp.potential ∧ (prepare p T sp).pred = sp.pred ∧
    (prepare p T sp).maxVehicles = sp.maxVehicles := by
  obtain ⟨c1, c2, c3, c4, c5, c6, c7, c8⟩ := prepare_fold p T sp hb p.nbClients (le_refl _)
  refine ⟨⟨c1, c2, c3, c4⟩, ⟨?_, ?_, ?_, ?_, ?_⟩, c6, c7, c8⟩
  · show ((prepare p T sp).cliSplit 0).dnext = 0
    unfold prepare
    rw [c5]; exact hb.dnext0
  · exact (c2 0 (Nat.zero_le _)).trans rfl
  · exact (c3 0 (Nat.zero_le _)).trans rfl
  · exact (c4 0 (Nat.zero_le _)).trans rfl
  · intro k j
    unfold prepare
    rw [c7]; exact hb.pred_le k j

end Split
namespace Split

theorem loadB_self (p : Params) (T : List Int) (i : Nat) : loadB p T i i = 0 := by
  cases i with
  | zero => rfl
  | succ i => simp [loadB]

theorem servB_self (p : Params) (T : List Int) (i : Nat) : servB p T i i = 0 := by
  cases i with
  | zero => rfl
  | succ i => simp [servB]

theorem distB_self (p : Params) (T : List Int) (i : Nat) : distB p T i i = 0 := by
  cases i with
  | zero => rfl
  | succ i => simp [distB]

theorem loadB_succ (p : Params) (T : List Int) {i j : Nat} (h : i ≤ j) :
    loadB p T i (j + 1) = fadd (loadB p T i j) (p.demand (cust T (j + 1))) := by
  simp only [loadB]
  rw [if_neg (by omega)]

theorem servB_succ (p : Params) (T : List Int) {i j : Nat} (h : i ≤ j) :
    servB p T i (j + 1) = fadd (servB p T i j) (p.serviceDuration (cust T (j + 1))) := by
  simp only [servB]
  rw [if_neg (by omega)]

theorem distB_first (p : Params) (T : List Int) (i : Nat) :
    distB p T i (i + 1) = fadd (distB p T i i) (p.timeCost 0 (cust T (i + 1))) := by
  simp [distB]

theorem distB_succ (p : Params) (T : List Int) {i j : Nat} (h : i < j) :
    distB p T i (j + 1) = fadd (distB p T i j) (client p T j).dnext := by
  simp only [distB]
  rw [if_neg (by omega), if_neg (by omega)]

theorem GuardFrom_step {p : Params} {T : List Int} {i j b : Nat} (hj : 1 ≤ j) (hb : j < b) :
    GuardFrom p T i j b ↔
      (loadB p T i (j - 1) ≤ fmul (3 / 2) p.vehicleCapacity ∧ GuardFrom p T i (j + 1) b) := by
  constructor
  · intro h
    refine ⟨h (j - 1) (by omega) (le_refl _), fun t h1 h2 => h t h1 ?_⟩
    simp only [Nat.add_sub_cancel] at h2
    omega
  · rintro ⟨h1, h2⟩ t g1 g2
    by_cases e : t = j - 1
    · rw [e]; exact h1
    · exact h2 t g1 (by simp only [Nat.add_sub_cancel]; omega)

theorem GuardFrom_self {p : Params} {T : List Int} {i j : Nat} (hj : 1 ≤ j) :
    GuardFrom p T i j j ↔ loadB p T i (j - 1) ≤ fmul (3 / 2) p.vehicleCapacity := by
  constructor
  · intro h
    exact h (j - 1) (by omega) (le_refl _)
  · intro h t g1 g2
    have : t = j - 1 := by omega
    rw [this]; exact h

/-- The inner loop of the Bellman algorithm, from source `i`: the cells of row `dst` at the
positions `b` that the loop reaches are relaxed with the cost of the route `i + 1 .. b`,
nothing else changes. -/
theorem bellman_inner_spec (p : Params) (T : List Int)
    (k dst i : Nat) : ∀ (m j : Nat) (load distance serviceDuration : ℚ) (sp : Split),
    Prepared p T sp → i < j → j + m = p.nbClients + 1 →
    load = loadB p T i (j - 1) →
    serviceDuration = servB p T i (j - 1) →
    distance = distB p T i (j - 1) →
    (bellman_inner p k dst i m j load distance serviceDuration sp).cliSplit = sp.cliSplit ∧
    (bellman_inner p k dst i m j load distance serviceDuration sp).sumLoad = sp.sumLoad ∧
    (bellman_inner p k dst i m j load distance serviceDuration sp).sumService = sp.sumService ∧
    (bellman_inner p k dst i m j load distance serviceDuration sp).sumDistance = sp.sumDistance ∧
    (bellman_inner p k dst i m j load distance serviceDuration sp).maxVehicles = sp.maxVehicles ∧
    (∀ a b, (bellman_inner p k dst i m j load distance serviceDuration sp).potential a b =
      if a = dst ∧ j ≤ b ∧ b ≤ p.nbClients ∧ GuardFrom p T i j b ∧
          fadd (sp.potential k i) (routeCost p T i b) < sp.potential dst b
      then fadd (sp.potential k i) (routeCost p T i b) else sp.potential a b) ∧
    (∀ a b, (bellman_inner p k dst i m j load distance serviceDuration sp).pred a b =
      if a = dst ∧ j ≤ b ∧ b ≤ p.nbClients ∧ GuardFrom p T i j b ∧
          fadd (sp.potential k i) (routeCost p T i b) < sp.potential dst b
      then i else sp.pred a b)
  | 0, j, load, distance, serviceDuration, sp, hP, hij, hm, hl, hs, hd => by
    have hunf : bellman_inner p k dst i 0 j load distance serviceDuration sp = sp := rfl
    rw [hunf]
    refine ⟨rfl, rfl, rfl, rfl, rfl, fun a b => ?_, fun a b => ?_⟩
    · rw [if_neg (fun h => by omega)]
    · rw [if_neg (fun h => by omega)]
  | m + 1, j, load, distance, serviceDuration, sp, hP, hij, hm, hl, hs, hd => by
    have hj1 : 1 ≤ j := by omega
    have hjn : j ≤ p.nbClients := by omega
    have e2 : j - 1 + 1 = j := by omega
    by_cases hg : load ≤ fmul (3 / 2) p.vehicleCapacity
    · have hload : fadd load (sp.cliSplit j).demand = loadB p T i j := by
        have := loadB_succ p T (show i ≤ j - 1 by omega)
        rw [e2] at this
        rw [this, hl, hP.cli j hj1 hjn]
        rfl
      have hserv : fadd serviceDuration (sp.cliSplit j).serviceTime = servB p T i j := by
        have := servB_succ p T (show i ≤ j - 1 by omega)
        rw [e2] at this
        rw [this, hs, hP.cli j hj1 hjn]
        rfl
      have hdist : (if j = i + 1 then fadd distance (sp.cliSplit j).d0_x
            else fadd distance (sp.cliSplit (j - 1)).dnext) = distB p T i j := by
        by_cases e : j = i + 1
        · rw [if_pos e, hd, hP.cli j hj1 hjn, e, distB_first]
          rfl
        · have := distB_succ p T (show i < j - 1 by omega)
          rw [e2] at this
          rw [if_neg e, hd, hP.cli (j - 1) (by omega) (by omega), this]
      have hrc : route_cost p (if j = i + 1 then fadd distance (sp.cliSplit j).d0_x
            else fadd distance (sp.cliSplit (j - 1)).dnext) (sp.cliSplit j).dx_0
            (fadd load (sp.cliSplit j).demand)
            (fadd serviceDuration (sp.cliSplit j).serviceTime) = routeCost p T i j := by
        rw [hdist, hload, hserv, hP.cli j hj1 hjn]
        rfl
      obtain ⟨c1, c2, c3, c4, c5, c6, c7⟩ := bellman_inner_spec p T k dst i m (j + 1)
        (fadd load (sp.cliSplit j).demand)
        (if j = i + 1 then fadd distance (sp.cliSplit j).d0_x
          else fadd distance (sp.cliSplit (j - 1)).dnext)
        (fadd serviceDuration (sp.cliSplit j).serviceTime)
        (if fadd (sp.potential k i) (routeCost p T i j) < sp.potential dst j then
          { sp with
            potential := upd2 sp.potential dst j (fadd (sp.potential k i) (routeCost p T i j)),
            pred := upd2 sp.pred dst j i }
        else sp)
        (by
          by_cases c : fadd (sp.potential k i) (routeCost p T i j) < sp.potential dst j
          · rw [if_pos c]; exact ⟨hP.cli, hP.load, hP.serv, hP.dist⟩
          · rw [if_neg c]; exact hP)
        (by omega) (by omega)
        (by simp only [Nat.add_sub_cancel]; exact hload)
        (by simp only [Nat.add_sub_cancel]; exact hserv)
        (by simp only [Nat.add_sub_cancel]; exact hdist)
      have hunf : bellman_inner p k dst i (m + 1) j load distance serviceDuration sp =
          bellman_inner p k dst i m (j + 1) (fadd load (sp.cliSplit j).demand)
            (if j = i + 1 then fadd distance (sp.cliSplit j).d0_x
              else fadd distance (sp.cliSplit (j - 1)).dnext)
            (fadd serviceDuration (sp.cliSplit j).serviceTime)
            (if fadd (sp.potential k i) (routeCost p T i j) < sp.potential dst j then
              { sp with
                potential :=
                  upd2 sp.potential dst j (fadd (sp.potential k i) (routeCost p T i j)),
                pred := upd2 sp.pred dst j i }
            else sp) := by
        rw [bellman_inner, if_pos hg]
        simp only [hrc]
      rw [hunf]
      have hg2 : loadB p T i (j - 1) ≤ fmul (3 / 2) p.vehicleCapacity := hl ▸ hg
      by_cases c : fadd (sp.potential k i) (routeCost p T i j) < sp.potential dst j
      · rw [if_pos c] at c1 c2 c3 c4 c5 c6 c7 ⊢
        refine ⟨c1, c2, c3, c4, c5, fun a b => ?_, fun a b => ?_⟩
        · rw [c6 a b]
          simp only
          have hki : upd2 sp.potential dst j (fadd (sp.potential k i) (routeCost p T i j)) k i =
              sp.potential k i := upd2_other _ _ _ _ _ _ (fun h => by omega)
          rw [hki]
          by_cases hb : b = j
          · subst hb
            by_cases ha : a = dst
            · subst ha
              rw [if_neg (fun h => by omega), upd2_same,
                if_pos ⟨rfl, le_refl _, hjn, (GuardFrom_self hj1).2 hg2, c⟩]
            · rw [if_neg (fun h => ha h.1), if_neg (fun h => ha h.1),
                upd2_other _ _ _ _ _ _ (fun h => ha h.1)]
          · have hdb : upd2 sp.potential dst j (fadd (sp.potential k i) (routeCost p T i j))
                dst b = sp.potential dst b := upd2_other _ _ _ _ _ _ (fun h => hb h.2)
            have hab : upd2 sp.potential dst j (fadd (sp.potential k i) (routeCost p T i j))
                a b = sp.potential a b := upd2_other _ _ _ _ _ _ (fun h => hb h.2)
            rw [hdb, hab]
            by_cases hc : a = dst ∧ j ≤ b ∧ b ≤ p.nbClients ∧ GuardFrom p T i j b ∧
                fadd (sp.potential k i) (routeCost p T i b) < sp.potential dst b
            · rw [if_pos hc, if_pos ⟨hc.1, by omega, hc.2.2.1,
                ((GuardFrom_step hj1 (by omega)).1 hc.2.2.2.1).2, hc.2.2.2.2⟩]
            · rw [if_neg hc, if_neg]
              rintro ⟨h1, h2, h3, h4, h5⟩
              exact hc ⟨h1, by omega, h3, (GuardFrom_step hj1 (by omega)).2 ⟨hg2, h4⟩, h5⟩
        · rw [c7 a b]
          simp only
          have hki : upd2 sp.potential dst j (fadd (sp.potential k i) (routeCost p T i j)) k i =
              sp.potential k i := upd2_other _ _ _ _ _ _ (fun h => by omega)
          rw [hki]
          by_cases hb : b = j
          · subst hb
            by_cases ha : a = dst
            · subst ha
              rw [if_neg (fun h => by omega), upd2_same,
                if_pos ⟨rfl, le_refl _, hjn, (GuardFrom_self hj1).2 hg2, c⟩]
            · rw [if_neg (fun h => ha h.1), if_neg (fun h => ha h.1),
                upd2_other _ _ _ _ _ _ (fun h => ha h.1)]
          · have hdb : upd2 sp.potential dst j (fadd (sp.potential k i) (routeCost p T i j))
                dst b = sp.potential dst b := upd2_other _ _ _ _ _ _ (fun h => hb h.2)
            have hab : upd2 sp.pred dst j i a b = sp.pred a b :=
              upd2_other _ _ _ _ _ _ (fun h => hb h.2)
            rw [hdb, hab]
            by_cases hc : a = dst ∧ j ≤ b ∧ b ≤ p.nbClients ∧ GuardFrom p T i j b ∧
                fadd (sp.potential k i) (routeCost p T i b) < sp.potential dst b
            · rw [if_pos hc, if_pos ⟨hc.1, by omega, hc.2.2.1,
                ((GuardFrom_step hj1 (by omega)).1 hc.2.2.2.1).2, hc.2.2.2.2⟩]
            · rw [if_neg hc, if_neg]
              rintro ⟨h1, h2, h3, h4, h5⟩
              exact hc ⟨h1, by omega, h3, (GuardFrom_step hj1 (by omega)).2 ⟨hg2, h4⟩, h5⟩
      · rw [if_neg c] at c1 c2 c3 c4 c5 c6 c7 ⊢
        refine ⟨c1, c2, c3, c4, c5, fun a b => ?_, fun a b => ?_⟩
        · rw [c6 a b]
          by_cases hc : a = dst ∧ j ≤ b ∧ b ≤ p.nbClients ∧ GuardFrom p T i j b ∧
              fadd (sp.potential k i) (routeCost p T i b) < sp.potential dst b
          · have hb : b ≠ j := fun e => c (e ▸ hc.2.2.2.2)
            rw [if_pos hc, if_pos ⟨hc.1, by omega, hc.2.2.1,
              ((GuardFrom_step hj1 (by omega)).1 hc.2.2.2.1).2, hc.2.2.2.2⟩]
          · rw [if_neg hc, if_neg]
            rintro ⟨h1, h2, h3, h4, h5⟩
            exact hc ⟨h1, by omega, h3, (GuardFrom_step hj1 (by omega)).2 ⟨hg2, h4⟩, h5⟩
        · rw [c7 a b]
          by_cases hc : a = dst ∧ j ≤ b ∧ b ≤ p.nbClients ∧ GuardFrom p T i j b ∧
              fadd (sp.potential k i) (routeCost p T i b) < sp.potential dst b
          · have hb : b ≠ j := fun e => c (e ▸ hc.2.2.2.2)
            rw [if_pos hc, if_pos ⟨hc.1, by omega, hc.2.2.1,
              ((GuardFrom_step hj1 (by omega)).1 hc.2.2.2.1).2, hc.2.2.2.2⟩]
          · rw [if_neg hc, if_neg]
            rintro ⟨h1, h2, h3, h4, h5⟩
            exact hc ⟨h1, by omega, h3, (GuardFrom_step hj1 (by omega)).2 ⟨hg2, h4⟩, h5⟩
    · have hunf : bellman_inner p k dst i (m + 1) j load distance serviceDuration sp = sp := by
        rw [bellman_inner, if_neg hg]
      rw [hunf]
      have hg2 : ¬ loadB p T i (j - 1) ≤ fmul (3 / 2) p.vehicleCapacity := hl ▸ hg
      refine ⟨rfl, rfl, rfl, rfl, rfl, fun a b => ?_, fun a b => ?_⟩
      · rw [if_neg]
        rintro ⟨h1, h2, h3, h4, h5⟩
        exact hg2 (h4 (j - 1) (by omega) (le_refl _))
      · rw [if_neg]
        rintro ⟨h1, h2, h3, h4, h5⟩
        exact hg2 (h4 (j - 1) (by omega) (le_refl _))

end Split
namespace Split

theorem clear_row_fold (p : Params) (k : Nat) (sp : Split) : ∀ n : Nat,
    let s := (List.range n).foldl
      (fun (s : Split) (m : Nat) => { s with potential := upd2 s.potential k (m + 1) INF }) sp
    s.cliSplit = sp.cliSplit ∧ s.sumLoad = sp.sumLoad ∧ s.sumService = sp.sumService ∧
    s.sumDistance = sp.sumDistance ∧ s.maxVehicles = sp.maxVehicles ∧ s.pred = sp.pred ∧
    (∀ a b, s.potential a b = if a = k ∧ 1 ≤ b ∧ b ≤ n then INF else sp.potential a b) := by
  intro n
  induction n with
  | zero =>
    refine ⟨rfl, rfl, rfl, rfl, rfl, rfl, fun a b => ?_⟩
    rw [if_neg (fun h => by omega)]
    rfl
  | succ n ih =>
    obtain ⟨c1, c2, c3, c4, c5, c6, c7⟩ := ih
    simp only [List.range_succ, List.foldl_append, List.foldl_cons, List.foldl_nil]
    refine ⟨c1, c2, c3, c4, c5, c6, fun a b => ?_⟩
    by_cases h : a = k ∧ b = n + 1
    · rw [h.1, h.2, upd2_same, if_pos ⟨rfl, by omega, le_refl _⟩]
    · rw [upd2_other _ _ _ _ _ _ h, c7 a b]
      by_cases h2 : a = k ∧ 1 ≤ b ∧ b ≤ n
      · rw [if_pos h2, if_pos ⟨h2.1, h2.2.1, by omega⟩]
      · rw [if_neg h2, if_neg]
        rintro ⟨g1, g2, g3⟩
        exact h2 ⟨g1, g2, by
          have : b ≠ n + 1 := fun e => h ⟨g1, e⟩
          omega⟩

/-- The loop that reinitialises row `k` of the potentials. -/
theorem clear_row_spec (p : Params) (k : Nat) (sp : Split) :
    (clear_row p k sp).cliSplit = sp.cliSplit ∧ (clear_row p k sp).sumLoad = sp.sumLoad ∧
    (clear_row p k sp).sumService = sp.sumService ∧
    (clear_row p k sp).sumDistance = sp.sumDistance ∧
    (clear_row p k sp).maxVehicles = sp.maxVehicles ∧ (clear_row p k sp).pred = sp.pred ∧
    (∀ a b, (clear_row p k sp).potential a b =
      if a = k ∧ 1 ≤ b ∧ b ≤ p.nbClients then INF else sp.potential a b) :=
  clear_row_fold p k sp p.nbClients

theorem Prepared.of_fields {p : Params} {T : List Int} {sp sp2 : Split} (h : Prepared p T sp)
    (h1 : sp2.cliSplit = sp.cliSplit) (h2 : sp2.sumLoad = sp.sumLoad)
    (h3 : sp2.sumService = sp.sumService) (h4 : sp2.sumDistance = sp.sumDistance) :
    Prepared p T sp2 :=
  ⟨fun i a b => by rw [h1]; exact h.cli i a b, fun i a => by rw [h2]; exact h.load i a,
    fun i a => by rw [h3]; exact h.serv i a, fun i a => by rw [h4]; exact h.dist i a⟩

theorem Guarded_iff_from (p : Params) (T : List Int) (i b : Nat) :
    GuardFrom p T i (i + 1) b ↔ Guarded p T i b := by
  unfold GuardFrom Guarded
  simp only [Nat.add_sub_cancel]

/-- The inner loop of the Bellman algorithm run from its start for the source `i`. -/
theorem bellman_source_spec (p : Params) (T : List Int) (hdur : p.isDurationConstraint = true)
    (k dst i : Nat) (sp : Split) (hP : Prepared p T sp) (hi : i ≤ p.nbClients) :
    Prepared p T (bellman_inner p k dst i (p.nbClients - i) (i + 1) 0 0 0 sp) ∧
    (bellman_inner p k dst i (p.nbClients - i) (i + 1) 0 0 0 sp).maxVehicles = sp.maxVehicles ∧
    (∀ a b, (bellman_inner p k dst i (p.nbClients - i) (i + 1) 0 0 0 sp).potential a b =
      if a = dst ∧ i < b ∧ b ≤ p.nbClients ∧ Guarded p T i b ∧
          fadd (sp.potential k i) (routeCost p T i b) < sp.potential dst b
      then fadd (sp.potential k i) (routeCost p T i b) else sp.potential a b) ∧
    (∀ a b, (bellman_inner p k dst i (p.nbClients - i) (i + 1) 0 0 0 sp).pred a b =
      if a = dst ∧ i < b ∧ b ≤ p.nbClients ∧ Guarded p T i b ∧
          fadd (sp.potential k i) (routeCost p T i b) < sp.potential dst b
      then i else sp.pred a b) := by
  obtain ⟨c1, c2, c3, c4, c5, c6, c7⟩ := bellman_inner_spec p T k dst i (p.nbClients - i)
    (i + 1) 0 0 0 sp hP (by omega) (by omega)
    (by simp only [Nat.add_sub_cancel]; exact (loadB_self p T i).symm)
    (by simp only [Nat.add_sub_cancel]; exact (servB_self p T i).symm)
    (by simp only [Nat.add_sub_cancel]; exact (distB_self p T i).symm)
  refine ⟨hP.of_fields c1 c2 c3 c4, c5, fun a b => ?_, fun a b => ?_⟩
  · rw [c6 a b]
    simp only [Guarded_iff_from, Nat.succ_le_iff]
  · rw [c7 a b]
    simp only [Guarded_iff_from, Nat.succ_le_iff]

end Split
namespace Split

theorem BellmanInv.bellman_source {p : Params} {T : List Int} (hdur : p.isDurationConstraint = true)
    {s0 s : Split} {i : Nat} (h : BellmanInv p T s0 s i) (hi : i < p.nbClients) :
    BellmanInv p T s0 (bellman_inner p 0 0 i (p.nbClients - i) (i + 1) 0 0 0 s) (i + 1) := by
  obtain ⟨c1, c2, c3, c4⟩ := bellman_source_spec p T hdur 0 0 i s h.prepared (by omega)
  have hsame : ∀ b, b ≤ i →
      (bellman_inner p 0 0 i (p.nbClients - i) (i + 1) 0 0 0 s).potential 0 b =
        s.potential 0 b := by
    intro b hb
    rw [c3 0 b, if_neg (fun g => by omega)]
  have hdecr : ∀ b, (bellman_inner p 0 0 i (p.nbClients - i) (i + 1) 0 0 0 s).potential 0 b ≤
        s.potential 0 b := by
    intro b
    rw [c3 0 b]
    split_ifs with g
    · exact le_of_lt g.2.2.2.2
    · exact le_refl _
  refine ⟨c1, c2.trans h.maxv, ?_, fun a b hab => ?_, fun j j1 jn => ?_, fun j j1 jn hlt => ?_,
    fun j jn i2 hi2 hij hg => ?_, fun h0 a b => ?_⟩
  · rw [hsame 0 (Nat.zero_le _)]; exact h.zero
  · rw [c3 a b, c4 a b, if_neg (fun g => by rcases hab with e | e <;> omega),
      if_neg (fun g => by rcases hab with e | e <;> omega)]
    exact h.rows a b hab
  · exact le_trans (hdecr j) (h.le_inf j j1 jn)
  · by_cases g : 0 = 0 ∧ i < j ∧ j ≤ p.nbClients ∧ Guarded p T i j ∧
        fadd (s.potential 0 i) (routeCost p T i j) < s.potential 0 j
    · have ep := c4 0 j
      have ej := c3 0 j
      rw [if_pos g] at ep ej
      rw [ep, ej, hsame i (le_refl _)]
      exact ⟨g.2.1, Nat.lt_succ_self _, g.2.2.2.1, rfl⟩
    · have ep := c4 0 j
      have ej := c3 0 j
      rw [if_neg g] at ep ej
      rw [ej] at hlt
      obtain ⟨l1, l2, l3, l4⟩ := h.last j j1 jn hlt
      rw [ep, ej, hsame _ (by omega)]
      exact ⟨l1, by omega, l3, l4⟩
  · rw [hsame i2 (by omega)]
    by_cases e : i2 = i
    · subst e
      rw [c3 0 j]
      split_ifs with g
      · exact le_refl _
      · by_contra hc
        exact g ⟨rfl, hij, jn, hg, lt_of_not_le hc⟩
    · exact le_trans (hdecr j) (h.relaxed j jn i2 (by omega) hij hg)
  · rw [c4 a b]
    split_ifs with g
    · exact le_of_lt g.2.1
    · exact h.pred_le h0 a b

theorem BellmanInv.bellman_fold {p : Params} {T : List Int} (hdur : p.isDurationConstraint = true)
    {s0 s : Split} (h : BellmanInv p T s0 s 0) : ∀ i : Nat, i ≤ p.nbClients →
    BellmanInv p T s0 ((List.range i).foldl
      (fun (s : Split) (i : Nat) => bellman_inner p 0 0 i (p.nbClients - i) (i + 1) 0 0 0 s) s) i
  | 0, _ => h
  | i + 1, hi => by
    simp only [List.range_succ, List.foldl_append, List.foldl_cons, List.foldl_nil]
    exact (BellmanInv.bellman_fold hdur h i (by omega)).bellman_source hdur (by omega)

/-- The state at the start of the main algorithm of `splitSimple`. -/
theorem BellmanInv.bellman_init {p : Params} {T : List Int} {sp : Split} (hP : Prepared p T sp) :
    BellmanInv p T sp (clear_row p 0 { sp with potential := upd2 sp.potential 0 0 0 }) 0 := by
  obtain ⟨c1, c2, c3, c4, c5, c6, c7⟩ :=
    clear_row_spec p 0 { sp with potential := upd2 sp.potential 0 0 0 }
  refine ⟨hP.of_fields c1 c2 c3 c4, c5, ?_, fun a b hab => ⟨?_, ?_⟩, fun j j1 jn => ?_,
    fun j j1 jn hlt => ?_, fun j jn i2 hi2 => absurd hi2 (Nat.not_lt_zero _),
    fun h0 a b => by rw [c6]; exact h0 a b⟩
  · rw [c7 0 0, if_neg (fun g => by omega)]
    exact upd2_same sp.potential 0 0 0
  · rw [c7 a b, if_neg (fun g => by rcases hab with e | e <;> omega)]
    exact upd2_other sp.potential 0 0 0 a b (fun g => by rcases hab with e | e <;> omega)
  · rw [c6]
  · rw [c7 0 j, if_pos ⟨rfl, j1, jn⟩]
  · rw [c7 0 j, if_pos ⟨rfl, j1, jn⟩] at hlt
    exact absurd hlt (lt_irrefl _)

end Split
namespace Split

theorem simple_potentials_dur (p : Params) (sp : Split) (hdur : p.isDurationConstraint = true) :
    simple_potentials p sp = (List.range p.nbClients).foldl
      (fun (s : Split) (i : Nat) => bellman_inner p 0 0 i (p.nbClients - i) (i + 1) 0 0 0 s)
      (clear_row p 0 { sp with potential := upd2 sp.potential 0 0 0 }) := by
  unfold simple_potentials
  simp only [hdur, if_true]

/-- The Bellman algorithm of `splitSimple` ends in a state where every source has been
processed. -/
theorem bellman_final {p : Params} {T : List Int} (hdur : p.isDurationConstraint = true)
    {sp : Split} (hP : Prepared p T sp) :
    BellmanInv p T sp (simple_potentials p sp) p.nbClients := by
  rw [simple_potentials_dur p sp hdur]
  exact (BellmanInv.bellman_init hP).bellman_fold hdur p.nbClients (le_refl _)

/-- No guarded split is cheaper than the potential. -/
theorem BellmanInv.optimal {p : Params} {T : List Int} {s0 s : Split}
    (h : BellmanInv p T s0 s p.nbClients) {j : Nat} {c : ℚ} (hc : Path p T j c) :
    s.potential 0 j ≤ c := by
  induction hc with
  | zero => exact le_of_eq h.zero
  | @step i j c hp hij hjn hg ih =>
    exact le_trans (h.relaxed j hjn i (by omega) hij hg) (fadd_mono_left _ ih)

theorem Path.singles {p : Params} {T : List Int} (hQ : 0 ≤ p.vehicleCapacity) : ∀ j : Nat,
    j ≤ p.nbClients → Path p T j (singlesTo p T j)
  | 0, _ => Path.zero
  | j + 1, hj => by
    refine Path.step (Path.singles hQ j (by omega)) (Nat.lt_succ_self _) hj ?_
    intro t h1 h2
    have : t = j := by omega
    subst this
    rw [loadB_self]
    exact fmul_nonneg (by norm_num) hQ

/-- With a sentinel above the cost of the one-customer routes every potential is the cost
of a guarded split. -/
theorem BellmanInv.attained {p : Params} {T : List Int} {s0 s : Split}
    (h : BellmanInv p T s0 s p.nbClients) (hQ : 0 ≤ p.vehicleCapacity)
    (hsmall : ∀ j, j ≤ p.nbClients → singlesTo p T j < INF) :
    ∀ j : Nat, j ≤ p.nbClients → Path p T j (s.potential 0 j) := by
  intro j
  induction j using Nat.strong_induction_on with
  | _ j ih =>
    intro hj
    by_cases h0 : j = 0
    · subst h0
      rw [h.zero]
      exact Path.zero
    · have hlt : s.potential 0 j < INF :=
        lt_of_le_of_lt (h.optimal (Path.singles hQ j hj)) (hsmall j hj)
      obtain ⟨l1, l2, l3, l4⟩ := h.last j (by omega) hj hlt
      rw [l4]
      exact Path.step (ih _ l1 (by omega)) l1 hj l3

end Split
namespace Split

theorem cutCostFrom_append (p : Params) (T : List Int) : ∀ (l : List Nat) (acc : ℚ) (i : Nat)
    (l2 : List Nat),
    cutCostFrom p T acc i (l ++ l2) = cutCostFrom p T (cutCostFrom p T acc i l) (i + l.sum) l2
  | [], acc, i, l2 => by simp [cutCostFrom]
  | x :: l, acc, i, l2 => by
    have ih := cutCostFrom_append p T l (fadd acc (routeCost p T i (i + x))) (i + x) l2
    rw [Nat.add_assoc] at ih
    show cutCostFrom p T (fadd acc (routeCost p T i (i + x))) (i + x) (l ++ l2) = _
    rw [ih, List.sum_cons]
    rfl

theorem GuardedCut_append (p : Params) (T : List Int) : ∀ (l : List Nat) (i : Nat)
    (l2 : List Nat),
    GuardedCut p T i (l ++ l2) ↔ (GuardedCut p T i l ∧ GuardedCut p T (i + l.sum) l2)
  | [], i, l2 => by simp [GuardedCut]
  | x :: l, i, l2 => by
    have ih := GuardedCut_append p T l (i + x) l2
    rw [Nat.add_assoc] at ih
    show (0 < x ∧ Guarded p T i (i + x) ∧ GuardedCut p T (i + x) (l ++ l2)) ↔ _
    rw [ih, List.sum_cons]
    simp only [GuardedCut]
    tauto

/-- A cost reached route after route is the cost of a guarded split given by the lengths
of its routes. -/
theorem Path.lens {p : Params} {T : List Int} {j : Nat} {c : ℚ} (h : Path p T j c) :
    ∃ lens : List Nat, GuardedCut p T 0 lens ∧ lens.sum = j ∧ cutCost p T 0 lens = c := by
  induction h with
  | zero => exact ⟨[], trivial, rfl, rfl⟩
  | @step i j c hp hij hjn hg ih =>
    obtain ⟨lens, g1, g2, g3⟩ := ih
    refine ⟨lens ++ [j - i], ?_, ?_, ?_⟩
    · rw [GuardedCut_append]
      refine ⟨g1, ?_⟩
      simp only [GuardedCut, Nat.zero_add, g2, and_true]
      have e : i + (j - i) = j := by omega
      rw [e]
      exact ⟨by omega, hg⟩
    · simp [g2]; omega
    · unfold cutCost at g3 ⊢
      rw [cutCostFrom_append, g3]
      simp only [cutCostFrom, Nat.zero_add, g2]
      have e : i + (j - i) = j := by omega
      rw [e]

/-- The cost of a guarded split given by the lengths of its routes is reached route after
route. -/
theorem Path.of_lens {p : Params} {T : List Int} : ∀ (lens : List Nat),
    GuardedCut p T 0 lens → lens.sum ≤ p.nbClients → Path p T lens.sum (cutCost p T 0 lens) := by
  intro lens
  induction lens using List.reverseRecOn with
  | nil => intro _ _; exact Path.zero
  | append_singleton l x ih =>
    intro hg hs
    rw [GuardedCut_append] at hg
    simp only [List.sum_append, List.sum_cons, List.sum_nil, add_zero] at hs ⊢
    unfold cutCost at ih ⊢
    rw [cutCostFrom_append]
    simp only [cutCostFrom, Nat.zero_add]
    obtain ⟨g1, g2, g3, _⟩ := hg
    simp only [Nat.zero_add] at g3
    exact Path.step (ih g1 (by omega)) (by omega) hs g3

end Split
namespace Split

theorem slice_append (T : List Int) {b m e : Nat} (h1 : b ≤ m) (h2 : m ≤ e) :
    slice T b m ++ slice T m e = slice T b e := by
  unfold slice
  have e1 : e - b = (m - b) + (e - m) := by omega
  rw [e1, List.range_add, List.map_append, List.map_map]
  congr 1
  apply List.map_congr_left
  intro t _
  simp only [Function.comp]
  have : b + (m - b + t) = m + t := by omega
  rw [this]

theorem slice_self (T : List Int) (b : Nat) : slice T b b = [] := by
  simp [slice]

theorem slice_full (T : List Int) : slice T 0 T.length = T := by
  unfold slice
  apply List.ext_getElem
  · simp
  · intro n h1 h2
    simp only [Nat.sub_zero, List.length_map, List.length_range] at h1
    simp [List.getD_eq_getElem?_getD, List.getElem?_eq_getElem h2]

/-- The loop that fills the routes: with predecessors that never exceed their position,
the routes `0 .. K - 1` are consecutive slices of the tour that together make up the slice
from the final `end` to the initial one; the other routes are not touched. -/
theorem fill_spec (T : List Int) (pred : Nat → Nat → Nat) (row : Nat → Nat)
    (hle : ∀ k j, pred k j ≤ j) : ∀ (K : Nat) (R : Nat → List Int) (e : Nat),
    (fill T pred row K R e).2 ≤ e ∧
    ((List.range K).map (fill T pred row K R e).1).flatten = slice T (fill T pred row K R e).2 e ∧
    (∀ k, K ≤ k → (fill T pred row K R e).1 k = R k)
  | 0, R, e => by
    simp [fill, slice_self]
  | K + 1, R, e => by
    obtain ⟨h1, h2, h3⟩ := fill_spec T pred row hle K (upd R K (slice T (pred (row K) e) e))
      (pred (row K) e)
    have hb := hle (row K) e
    simp only [fill]
    refine ⟨le_trans h1 hb, ?_, fun k hk => ?_⟩
    · rw [List.range_succ, List.map_append, List.flatten_append, h2]
      simp only [List.map_cons, List.map_nil, List.flatten_cons, List.flatten_nil, List.append_nil]
      rw [h3 K (le_refl _), upd_same]
      exact slice_append T h1 hb
    · rw [h3 k (by omega), upd_other _ _ _ _ (by omega)]

theorem clear_routes_fold (N : Nat) (R : Nat → List Int) : ∀ m : Nat, m ≤ N →
    ∀ k, (List.range m).foldl
      (fun (c : Nat → List Int) (t : Nat) => upd c (N - 1 - t) []) R k =
      if N - m ≤ k ∧ k < N then [] else R k
  | 0, _, k => by
    simp only [List.range_zero, List.foldl_nil, Nat.sub_zero]
    rw [if_neg (fun h => by omega)]
  | m + 1, hm, k => by
    simp only [List.range_succ, List.foldl_append, List.foldl_cons, List.foldl_nil]
    by_cases e : k = N - 1 - m
    · rw [e, upd_same, if_pos ⟨by omega, by omega⟩]
    · rw [upd_other _ _ _ _ e, clear_routes_fold N R m (by omega) k]
      by_cases h : N - m ≤ k ∧ k < N
      · rw [if_pos h, if_pos ⟨by omega, h.2⟩]
      · rw [if_neg h, if_neg (fun g => h ⟨by omega, g.2⟩)]

/-- The loop that clears the routes `lo .. nbVehicles - 1`. -/
theorem clear_routes_spec (p : Params) (lo : Nat) (R : Nat → List Int) (k : Nat) :
    clear_routes p lo R k = if lo ≤ k ∧ k < p.nbVehicles then [] else R k := by
  unfold clear_routes
  rw [clear_routes_fold p.nbVehicles R (p.nbVehicles - lo) (by omega) k]
  by_cases h : lo ≤ k ∧ k < p.nbVehicles
  · rw [if_pos h, if_pos ⟨by omega, h.2⟩]
  · rw [if_neg h, if_neg (fun g => h ⟨by omega, g.2⟩)]

theorem flatten_range_nil (R : Nat → List Int) (K : Nat) : ∀ N : Nat, K ≤ N →
    (∀ k, K ≤ k → k < N → R k = []) →
    ((List.range N).map R).flatten = ((List.range K).map R).flatten
  | 0, h, _ => by
    have : K = 0 := by omega
    rw [this]
  | N + 1, h, hR => by
    by_cases e : K = N + 1
    · rw [e]
    · rw [List.range_succ, List.map_append, List.flatten_append,
        flatten_range_nil R K N (by omega) (fun k h1 h2 => hR k h1 (by omega))]
      simp [hR N (by omega) (Nat.lt_succ_self _)]

/-- The routes after the clearing and the filling loops, when the filling loop ends at
position 0: in the order of their indices they make up the tour. -/
theorem routes_join (p : Params) (T : List Int) (hT : T.length = p.nbClients)
    (pred : Nat → Nat → Nat) (row : Nat → Nat) (hle : ∀ k j, pred k j ≤ j) (K : Nat)
    (hK : K ≤ p.nbVehicles) (R : Nat → List Int)
    (hend : (fill T pred row K (clear_routes p K R) p.nbClients).2 = 0) :
    ((List.range p.nbVehicles).map
      (fill T pred row K (clear_routes p K R) p.nbClients).1).flatten = T := by
  obtain ⟨h1, h2, h3⟩ := fill_spec T pred row hle K (clear_routes p K R) p.nbClients
  rw [flatten_range_nil _ K p.nbVehicles hK (fun k g1 g2 => by
    rw [h3 k g1, clear_routes_spec, if_pos ⟨g1, g2⟩]), h2, hend, ← hT]
  exact slice_full T

end Split
namespace Split

theorem fill_end (T : List Int) (pred : Nat → Nat → Nat) (row : Nat → Nat) :
    ∀ (K : Nat) (R : Nat → List Int) (e : Nat), (fill T pred row K R e).2 = chain pred row K e
  | 0, _, _ => rfl
  | K + 1, R, e => by
    simp only [fill, chain]
    exact fill_end T pred row K _ _

theorem pop_back_loop_spec (p : Params) (sp : Split) (k i : Nat) : ∀ (m : Nat)
    (q : Trivial_Deque), q.indexFront ≤ q.indexBack + 1 →
    (pop_back_loop p sp k i m q).indexFront = q.indexFront ∧
    (pop_back_loop p sp k i m q).myDeque = q.myDeque ∧
    (pop_back_loop p sp k i m q).indexBack ≤ q.indexBack ∧
    q.indexFront ≤ (pop_back_loop p sp k i m q).indexBack + 1
  | 0, q, h => ⟨rfl, rfl, le_refl _, h⟩
  | m + 1, q, h => by
    unfold pop_back_loop
    by_cases c : 0 < q.size ∧ sp.dominatesRight p q.get_back i k = true
    · rw [if_pos c]
      have hs : 0 < q.indexBack - q.indexFront + 1 := c.1
      obtain ⟨a1, a2, a3, a4⟩ := pop_back_loop_spec p sp k i m q.pop_back
        (by simp only [Trivial_Deque.pop_back]; omega)
      refine ⟨a1, a2, ?_, a4⟩
      have : q.pop_back.indexBack = q.indexBack - 1 := rfl
      omega
    · rw [if_neg c]
      exact ⟨rfl, rfl, le_refl _, h⟩

theorem pop_front_loop_spec (p : Params) (sp : Split) (k i : Nat) : ∀ (m : Nat)
    (q : Trivial_Deque), q.indexFront ≤ q.indexBack →
    (pop_front_loop p sp k i m q).indexBack = q.indexBack ∧
    (pop_front_loop p sp k i m q).myDeque = q.myDeque ∧
    q.indexFront ≤ (pop_front_loop p sp k i m q).indexFront ∧
    (pop_front_loop p sp k i m q).indexFront ≤ q.indexBack
  | 0, q, h => ⟨rfl, rfl, le_refl _, h⟩
  | m + 1, q, h => by
    unfold pop_front_loop
    by_cases c : 1 < q.size ∧
        sp.propagate p q.get_front (i + 1) k >
          fsub (sp.propagate p q.get_next_front (i + 1) k) p.EPS
    · rw [if_pos c]
      have hs : 1 < q.indexBack - q.indexFront + 1 := c.1
      obtain ⟨a1, a2, a3, a4⟩ := pop_front_loop_spec p sp k i m q.pop_front
        (by simp only [Trivial_Deque.pop_front]; omega)
      refine ⟨a1, a2, ?_, a4⟩
      have : q.pop_front.indexFront = q.indexFront + 1 := rfl
      omega
    · rw [if_neg c]
      exact ⟨rfl, rfl, le_refl _, h⟩

end Split

theorem Trivial_Deque.All.front {q : Trivial_Deque} {P : Nat → Prop} (h : q.All P) :
    P q.get_front := h.2 _ (le_refl _) h.1

theorem Trivial_Deque.All.back {q : Trivial_Deque} {P : Nat → Prop} (h : q.All P) :
    P q.get_back := h.2 _ h.1 (le_refl _)

theorem Trivial_Deque.All.mono {q : Trivial_Deque} {P R : Nat → Prop} (h : q.All P)
    (hPR : ∀ d, P d → R d) : q.All R := ⟨h.1, fun t a b => hPR _ (h.2 t a b)⟩

namespace Split

theorem update_queue_all (p : Params) (k : Nat) (sp2 : Split) (q : Trivial_Deque) (i : Nat)
    {P : Nat → Prop} (hq : q.All P) : (update_queue p k sp2 q i).All (fun d => P d ∨ d = i) := by
  unfold update_queue
  have hq1 : (if sp2.dominates p q.get_back i k = false then
      (pop_back_loop p sp2 k i q.size.toNat q).push_back i else q).All
      (fun d => P d ∨ d = i) := by
    by_cases c : sp2.dominates p q.get_back i k = false
    · rw [if_pos c]
      obtain ⟨a1, a2, a3, a4⟩ := pop_back_loop_spec p sp2 k i q.size.toNat q
        (by have := hq.1; omega)
      refine ⟨?_, fun t h1 h2 => ?_⟩
      · simp only [Trivial_Deque.push_back, a1]; omega
      · simp only [Trivial_Deque.push_back, a1, a2] at h1 h2 ⊢
        by_cases e : t = (pop_back_loop p sp2 k i q.size.toNat q).indexBack + 1
        · rw [e, upd_same]; exact Or.inr rfl
        · rw [upd_other _ _ _ _ e]
          exact Or.inl (hq.2 t h1 (by omega))
    · rw [if_neg c]
      exact hq.mono (fun d h => Or.inl h)
  simp only
  generalize (if sp2.dominates p q.get_back i k = false then
      (pop_back_loop p sp2 k i q.size.toNat q).push_back i else q) = q1 at hq1
  obtain ⟨b1, b2, b3, b4⟩ := pop_front_loop_spec p sp2 k i q1.size.toNat q1 hq1.1
  refine ⟨by omega, fun t h1 h2 => ?_⟩
  rw [b2]
  exact hq1.2 t (by omega) (by omega)

/-- One iteration of the linear algorithm: the cell of position `i` receives the value
propagated from the front of the queue, and the new queue is not empty and holds elements
of the old queue and possibly `i`. -/
theorem deque_step_spec (p : Params) (k dst : Nat) (sp : Split) (q : Trivial_Deque) (i : Nat)
    {P : Nat → Prop} (hq : q.All P) :
    (deque_step p k dst sp q i).1 = write_front p k dst sp q i ∧
    (deque_step p k dst sp q i).2.All (fun d => P d ∨ d = i) := by
  unfold deque_step
  by_cases hi : i < p.nbClients
  · rw [if_pos hi]
    exact ⟨rfl, update_queue_all p k _ q i hq⟩
  · rw [if_neg hi]
    exact ⟨rfl, hq.mono (fun d h => Or.inl h)⟩

theorem write_front_fields (p : Params) (k dst : Nat) (sp : Split) (q : Trivial_Deque) (i : Nat) :
    (write_front p k dst sp q i).potential =
      upd2 sp.potential dst i (sp.propagate p q.get_front i k) ∧
    (write_front p k dst sp q i).pred = upd2 sp.pred dst i q.get_front ∧
    (write_front p k dst sp q i).cliSplit = sp.cliSplit ∧
    (write_front p k dst sp q i).sumLoad = sp.sumLoad ∧
    (write_front p k dst sp q i).sumService = sp.sumService ∧
    (write_front p k dst sp q i).sumDistance = sp.sumDistance ∧
    (write_front p k dst sp q i).maxVehicles = sp.maxVehicles :=
  ⟨rfl, rfl, rfl, rfl, rfl, rfl, rfl⟩

/-- The value `propagate(i, j, k)` in terms of the tour. -/
theorem propagate_eq {p : Params} {T : List Int} {sp : Split} (hP : Prepared p T sp)
    (hdur : p.isDurationConstraint = false) {i j : Nat} (hij : i < j) (hj : j ≤ p.nbClients)
    (k : Nat) : sp.propagate p i j k = propagateFrom p T (sp.potential k i) i j := by
  unfold propagate propagateFrom
  rw [hP.dist j hj, hP.dist (i + 1) (by omega), hP.cli (i + 1) (by omega) (by omega),
    hP.cli j (by omega) hj, hP.load j hj, hP.load i (by omega)]
  rfl

end Split
namespace Split

theorem DequeInv.deque_step_inv {p : Params} {T : List Int} (hdur : p.isDurationConstraint = false)
    {s0 s : Split} {i : Nat} (h : DequeInv p T s0 s i) (hi1 : 1 ≤ i) (hin : i ≤ p.nbClients)
    {q : Trivial_Deque} (hq : q.All (fun d => d < i)) :
    DequeInv p T s0 (deque_step p 0 0 s q i).1 (i + 1) ∧
    (deque_step p 0 0 s q i).2.All (fun d => d < i + 1) := by
  obtain ⟨e1, e2⟩ := deque_step_spec p 0 0 s q i hq
  obtain ⟨f1, f2, f3, f4, f5, f6, f7⟩ := write_front_fields p 0 0 s q i
  have hfront : q.get_front < i := hq.front
  rw [e1]
  refine ⟨⟨h.prepared.of_fields f3 f4 f5 f6, f7.trans h.maxv, ?_, fun a b hab => ?_, ?_,
    fun j hj => ?_, fun j j1 ji => ?_⟩, e2.mono (fun d hd => by rcases hd with g | g <;> omega)⟩
  · rw [f1, upd2_other _ _ _ _ _ _ (fun g => by omega)]
    exact h.zero
  · rw [f1, f2, upd2_other _ _ _ _ _ _ (fun g => by rcases hab with e | e <;> omega),
      upd2_other _ _ _ _ _ _ (fun g => by rcases hab with e | e <;> omega)]
    exact h.rows a b hab
  · rw [f2, upd2_other _ _ _ _ _ _ (fun g => by omega)]
    exact h.pred_zero
  · rw [f2, upd2_other _ _ _ _ _ _ (fun g => by omega)]
    exact h.pred_rest j (by omega)
  · by_cases e : j = i
    · subst e
      rw [f1, f2, upd2_same, upd2_same, upd2_other _ _ _ _ _ _ (fun g => by omega),
        propagate_eq h.prepared hdur hfront hin]
      exact ⟨hfront, rfl⟩
    · obtain ⟨w1, w2⟩ := h.written j j1 (by omega)
      rw [f1, f2, upd2_other _ _ _ _ _ _ (fun g => e g.2),
        upd2_other _ _ _ _ _ _ (fun g => e g.2), upd2_other _ _ _ _ _ _ (fun g => by omega)]
      exact ⟨w1, w2⟩

theorem DequeInv.deque_loop_inv {p : Params} {T : List Int} (hdur : p.isDurationConstraint = false)
    {s0 : Split} : ∀ (m i : Nat) (s : Split) (q : Trivial_Deque), DequeInv p T s0 s i →
    1 ≤ i → i + m = p.nbClients + 1 → q.All (fun d => d < i) →
    DequeInv p T s0 (deque_loop_simple p m i s q) (p.nbClients + 1)
  | 0, i, s, q, h, _, hm, _ => by
    have : i = p.nbClients + 1 := by omega
    subst this
    exact h
  | m + 1, i, s, q, h, hi, hm, hq => by
    obtain ⟨a1, a2⟩ := h.deque_step_inv hdur hi (by omega) hq
    exact DequeInv.deque_loop_inv hdur m (i + 1) _ _ a1 (by omega) (by omega) a2

theorem DequeInv.deque_init {p : Params} {T : List Int} {sp : Split} (hP : Prepared p T sp) :
    DequeInv p T sp (clear_row p 0 { sp with potential := upd2 sp.potential 0 0 0 }) 1 := by
  obtain ⟨c1, c2, c3, c4, c5, c6, c7⟩ :=
    clear_row_spec p 0 { sp with potential := upd2 sp.potential 0 0 0 }
  refine ⟨hP.of_fields c1 c2 c3 c4, c5, ?_, fun a b hab => ⟨?_, ?_⟩, ?_, fun j _ => ?_,
    fun j j1 ji => by omega⟩
  · rw [c7 0 0, if_neg (fun g => by omega)]
    exact upd2_same sp.potential 0 0 0
  · rw [c7 a b, if_neg (fun g => by rcases hab with e | e <;> omega)]
    exact upd2_other sp.potential 0 0 0 a b (fun g => by rcases hab with e | e <;> omega)
  · rw [c6]
  · rw [c6]
  · rw [c6]

theorem create_all (i : Nat) : (Trivial_Deque.create 0).All (fun d => d < i + 1) := by
  refine ⟨le_refl _, fun t h1 h2 => ?_⟩
  have h3 : (0 : Int) ≤ t := h1
  have h4 : t ≤ (0 : Int) := h2
  have : t = 0 := by omega
  subst this
  simp [Trivial_Deque.create, upd]

theorem simple_potentials_lin (p : Params) (sp : Split) (hdur : p.isDurationConstraint = false) :
    simple_potentials p sp = deque_loop_simple p p.nbClients 1
      (clear_row p 0 { sp with potential := upd2 sp.potential 0 0 0 }) (Trivial_Deque.create 0) := by
  unfold simple_potentials
  simp only [hdur]
  rfl

/-- The linear algorithm of `splitSimple` ends in a state where the cell of every position
holds the value propagated from its predecessor. -/
theorem deque_final {p : Params} {T : List Int} (hdur : p.isDurationConstraint = false)
    {sp : Split} (hP : Prepared p T sp) :
    DequeInv p T sp (simple_potentials p sp) (p.nbClients + 1) := by
  rw [simple_potentials_lin p sp hdur]
  exact DequeInv.deque_loop_inv hdur p.nbClients 1 _ _ (DequeInv.deque_init hP) (le_refl _) (by omega)
    (create_all 0)

end Split
namespace Split

theorem LevelInv.level_source {p : Params} {T : List Int} (hdur : p.isDurationConstraint = true)
    {s0 s : Split} {k i : Nat} (h : LevelInv p T s0 s k i) (hki : k ≤ i) (hi : i < p.nbClients)
    (hlim : s.potential k i < LIM) :
    LevelInv p T s0 (bellman_inner p k (k + 1) i (p.nbClients - i) (i + 1) 0 0 0 s) k (i + 1) := by
  obtain ⟨c1, c2, c3, c4⟩ := bellman_source_spec p T hdur k (k + 1) i s h.prepared (by omega)
  have hrowk : ∀ b, (bellman_inner p k (k + 1) i (p.nbClients - i) (i + 1) 0 0 0 s).potential k b =
      s.potential k b := by
    intro b
    rw [c3 k b, if_neg (fun g => by omega)]
  have hdecr : ∀ b,
      (bellman_inner p k (k + 1) i (p.nbClients - i) (i + 1) 0 0 0 s).potential (k + 1) b ≤
        s.potential (k + 1) b := by
    intro b
    rw [c3 (k + 1) b]
    split_ifs with g
    · exact le_of_lt g.2.2.2.2
    · exact le_refl _
  refine ⟨c1, c2.trans h.maxv, fun a b hab => ?_, fun b => le_trans (hdecr b) (h.decr b),
    fun j hlt => ?_, fun j jn i2 hk2 hi2 hij hg => ?_, fun j hj => ?_⟩
  · rw [c3 a b, c4 a b, if_neg (fun g => by rcases hab with e | e | e <;> omega),
      if_neg (fun g => by rcases hab with e | e | e <;> omega)]
    exact h.rows a b hab
  · have ep := c4 (k + 1) j
    have ej := c3 (k + 1) j
    by_cases g : k + 1 = k + 1 ∧ i < j ∧ j ≤ p.nbClients ∧ Guarded p T i j ∧
        fadd (s.potential k i) (routeCost p T i j) < s.potential (k + 1) j
    · rw [if_pos g] at ep ej
      rw [ep, ej, hrowk]
      exact ⟨hki, g.2.1, Nat.lt_succ_self _, g.2.2.2.1, rfl, hlim⟩
    · rw [if_neg g] at ep ej
      rw [ej] at hlt
      obtain ⟨l0, l1, l2, l3, l4, l5⟩ := h.last j hlt
      rw [ep, ej, hrowk]
      exact ⟨l0, l1, by omega, l3, l4, l5⟩
  · rw [hrowk]
    by_cases e : i2 = i
    · subst e
      rw [c3 (k + 1) j]
      split_ifs with g
      · exact le_refl _
      · by_contra hc
        exact g ⟨rfl, hij, jn, hg, lt_of_not_le hc⟩
    · exact le_trans (hdecr j) (h.relaxed j jn i2 hk2 (by omega) hij hg)
  · have ep := c4 (k + 1) j
    have ej := c3 (k + 1) j
    by_cases g : k + 1 = k + 1 ∧ i < j ∧ j ≤ p.nbClients ∧ Guarded p T i j ∧
        fadd (s.potential k i) (routeCost p T i j) < s.potential (k + 1) j
    · rw [if_pos g] at ej
      rw [ej] at hj
      have := h.decr j
      have := g.2.2.2.2
      linarith
    · rw [if_neg g] at ep ej
      rw [ep]
      rw [ej] at hj
      exact h.same j hj

/-- The loop over the sources of level `k` stops at some position `e`: all sources before
`e` have been processed, and either `e` is the last position or the potential of `e` is
not below the limit. -/
theorem LevelInv.level_loop {p : Params} {T : List Int} (hdur : p.isDurationConstraint = true)
    {s0 : Split} {k : Nat} : ∀ (m i : Nat) (s : Split), LevelInv p T s0 s k i → k ≤ i →
    i + m = p.nbClients →
    ∃ e, i ≤ e ∧ e ≤ p.nbClients ∧ LevelInv p T s0 (lf_bellman_level p k m i s) k e ∧
      (e < p.nbClients → ¬ (lf_bellman_level p k m i s).potential k e < LIM)
  | 0, i, s, h, _, hm => ⟨i, le_refl _, by omega, h, fun g => by omega⟩
  | m + 1, i, s, h, hki, hm => by
    unfold lf_bellman_level
    by_cases c : s.potential k i < LIM
    · rw [if_pos c]
      obtain ⟨e, e1, e2, e3, e4⟩ := LevelInv.level_loop hdur m (i + 1) _ (h.level_source hdur hki (by omega) c)
        (by omega) (by omega)
      exact ⟨e, by omega, e2, e3, e4⟩
    · rw [if_neg c]
      exact ⟨i, le_refl _, by omega, h, fun _ => c⟩

theorem LevelInv.level_start {p : Params} {T : List Int} {s : Split} (hP : Prepared p T s) (k : Nat) :
    LevelInv p T s s k k :=
  ⟨hP, rfl, fun _ _ _ => ⟨rfl, rfl⟩, fun _ => le_refl _, fun j h => absurd h (lt_irrefl _),
    fun j _ i2 h1 h2 => by omega, fun _ _ => rfl⟩

end Split
namespace Split

theorem LFDurInv.lfdur_level {p : Params} {T : List Int} (hdur : p.isDurationConstraint = true)
    {K k : Nat} {s : Split} (h : LFDurInv p T K s k) (hk : k < K) :
    LFDurInv p T K (lf_bellman_level p k (p.nbClients - k) k s) (k + 1) ∧
    (lf_bellman_level p k (p.nbClients - k) k s).maxVehicles = s.maxVehicles ∧
    ∃ e, k ≤ e ∧ LevelInv p T s (lf_bellman_level p k (p.nbClients - k) k s) k e ∧
      (k ≤ p.nbClients → e ≤ p.nbClients ∧
        (e < p.nbClients → ¬ (lf_bellman_level p k (p.nbClients - k) k s).potential k e < LIM)) := by
  have key : ∃ e, k ≤ e ∧ LevelInv p T s (lf_bellman_level p k (p.nbClients - k) k s) k e ∧
      (k ≤ p.nbClients → e ≤ p.nbClients ∧
        (e < p.nbClients →
          ¬ (lf_bellman_level p k (p.nbClients - k) k s).potential k e < LIM)) := by
    by_cases hkn : k ≤ p.nbClients
    · obtain ⟨e, e1, e2, e3, e4⟩ := LevelInv.level_loop hdur (p.nbClients - k) k s
        (LevelInv.level_start h.prepared k) (le_refl _) (by omega)
      exact ⟨e, e1, e3, fun _ => ⟨e2, e4⟩⟩
    · have e0 : p.nbClients - k = 0 := by omega
      rw [e0]
      exact ⟨k, le_refl _, LevelInv.level_start h.prepared k, fun g => absurd g hkn⟩
  obtain ⟨e, e1, L, e2⟩ := key
  refine ⟨⟨L.prepared, ?_, fun j j1 jn => ?_, fun k2 h1 h2 j j1 jn hlt => ?_,
    fun k2 h1 h2 j j1 jn => ?_, fun k2 h1 h2 j j1 jn => ?_, fun a b => ?_⟩, L.maxv, e, e1, L, e2⟩
  · rw [(L.rows 0 0 (Or.inl (by omega))).1]; exact h.zero
  · rw [(L.rows 0 j (Or.inl (by omega))).1]; exact h.row0 j j1 jn
  · by_cases c : k2 = k + 1
    · subst c
      have hc := h.cleared (k + 1) (by omega) (by omega) j j1 jn
      have hlt2 : (lf_bellman_level p k (p.nbClients - k) k s).potential (k + 1) j <
          s.potential (k + 1) j := by rw [hc]; exact hlt
      obtain ⟨l0, l1, l2, l3, l4, l5⟩ := L.last j hlt2
      simp only [Nat.add_sub_cancel]
      exact ⟨l0, l1, l3, l4, l5⟩
    · have r1 := L.rows k2 j (Or.inl c)
      rw [r1.1] at hlt
      obtain ⟨f1, f2, f3, f4, f5⟩ := h.fin k2 h1 (by omega) j j1 jn hlt
      have r2 := L.rows (k2 - 1) (s.pred k2 j) (Or.inl (by omega))
      rw [r1.1, r1.2, r2.1]
      exact ⟨f1, f2, f3, f4, f5⟩
  · by_cases c : k2 = k + 1
    · subst c
      exact le_trans (L.decr j) (h.le_inf (k + 1) h1 h2 j j1 jn)
    · rw [(L.rows k2 j (Or.inl c)).1]
      exact h.le_inf k2 h1 h2 j j1 jn
  · rw [(L.rows k2 j (Or.inl (by omega))).1]
    exact h.cleared k2 (by omega) h2 j j1 jn
  · by_cases c : a = k + 1
    · subst c
      by_cases c2 : (lf_bellman_level p k (p.nbClients - k) k s).potential (k + 1) b =
          s.potential (k + 1) b
      · rw [L.same b c2]; exact h.pred_le _ _
      · have := L.decr b
        exact le_of_lt (L.last b (lt_of_le_of_ne this c2)).2.1
    · rw [(L.rows a b (Or.inl c)).2]; exact h.pred_le _ _

theorem LFDurInv.lfdur_fold {p : Params} {T : List Int} (hdur : p.isDurationConstraint = true)
    {K : Nat} {s : Split} (h : LFDurInv p T K s 0) : ∀ k : Nat, k ≤ K →
    LFDurInv p T K ((List.range k).foldl
      (fun (s : Split) (k : Nat) => lf_bellman_level p k (p.nbClients - k) k s) s) k ∧
    ((List.range k).foldl
      (fun (s : Split) (k : Nat) => lf_bellman_level p k (p.nbClients - k) k s) s).maxVehicles =
      s.maxVehicles
  | 0, _ => ⟨h, rfl⟩
  | k + 1, hk => by
    simp only [List.range_succ, List.foldl_append, List.foldl_cons, List.foldl_nil]
    obtain ⟨a1, a2⟩ := LFDurInv.lfdur_fold hdur h k (by omega)
    obtain ⟨b1, b2, _⟩ := a1.lfdur_level hdur (by omega)
    exact ⟨b1, b2.trans a2⟩

theorem clear_rows_fold (p : Params) (sp : Split) : ∀ m : Nat,
    let s := (List.range m).foldl (fun (s : Split) (k : Nat) => clear_row p k s) sp
    s.cliSplit = sp.cliSplit ∧ s.sumLoad = sp.sumLoad ∧ s.sumService = sp.sumService ∧
    s.sumDistance = sp.sumDistance ∧ s.maxVehicles = sp.maxVehicles ∧ s.pred = sp.pred ∧
    (∀ a b, s.potential a b =
      if a < m ∧ 1 ≤ b ∧ b ≤ p.nbClients then INF else sp.potential a b) := by
  intro m
  induction m with
  | zero =>
    refine ⟨rfl, rfl, rfl, rfl, rfl, rfl, fun a b => ?_⟩
    rw [if_neg (fun h => by omega)]
    rfl
  | succ m ih =>
    obtain ⟨c1, c2, c3, c4, c5, c6, c7⟩ := ih
    simp only [List.range_succ, List.foldl_append, List.foldl_cons, List.foldl_nil]
    obtain ⟨d1, d2, d3, d4, d5, d6, d7⟩ := clear_row_spec p m
      ((List.range m).foldl (fun (s : Split) (k : Nat) => clear_row p k s) sp)
    refine ⟨d1.trans c1, d2.trans c2, d3.trans c3, d4.trans c4, d5.trans c5, d6.trans c6,
      fun a b => ?_⟩
    rw [d7 a b]
    by_cases g : a = m ∧ 1 ≤ b ∧ b ≤ p.nbClients
    · rw [if_pos g, if_pos ⟨by omega, g.2.1, g.2.2⟩]
    · rw [if_neg g, c7 a b]
      by_cases g2 : a < m ∧ 1 ≤ b ∧ b ≤ p.nbClients
      · rw [if_pos g2, if_pos ⟨by omega, g2.2.1, g2.2.2⟩]
      · rw [if_neg g2, if_neg]
        rintro ⟨g3, g4, g5⟩
        by_cases e : a = m
        · exact g ⟨e, g4, g5⟩
        · exact g2 ⟨by omega, g4, g5⟩

/-- The state after the reinitialisation of the rows `0 .. K` in `splitLF`. -/
theorem lf_init_spec (p : Params) (K : Nat) (sp : Split) :
    let s := (List.range (K + 1)).foldl (fun (s : Split) (k : Nat) => clear_row p k s)
      { sp with potential := upd2 sp.potential 0 0 0 }
    s.cliSplit = sp.cliSplit ∧ s.sumLoad = sp.sumLoad ∧ s.sumService = sp.sumService ∧
    s.sumDistance = sp.sumDistance ∧ s.maxVehicles = sp.maxVehicles ∧ s.pred = sp.pred ∧
    s.potential 0 0 = 0 ∧
    (∀ a b, a ≤ K → 1 ≤ b → b ≤ p.nbClients → s.potential a b = INF) := by
  obtain ⟨c1, c2, c3, c4, c5, c6, c7⟩ :=
    clear_rows_fold p { sp with potential := upd2 sp.potential 0 0 0 } (K + 1)
  refine ⟨c1, c2, c3, c4, c5, c6, ?_, fun a b ha b1 bn => ?_⟩
  · rw [c7 0 0, if_neg (fun g => by omega)]
    exact upd2_same sp.potential 0 0 0
  · rw [c7 a b, if_pos ⟨by omega, b1, bn⟩]

theorem LFDurInv.lfdur_init {p : Params} {T : List Int} {sp : Split} (hP : Prepared p T sp)
    (hb : ∀ a b, sp.pred a b ≤ b) (K : Nat) :
    LFDurInv p T K ((List.range (K + 1)).foldl (fun (s : Split) (k : Nat) => clear_row p k s)
      { sp with potential := upd2 sp.potential 0 0 0 }) 0 := by
  obtain ⟨c1, c2, c3, c4, c5, c6, c7, c8⟩ := lf_init_spec p K sp
  refine ⟨hP.of_fields c1 c2 c3 c4, c7, fun j j1 jn => c8 0 j (Nat.zero_le _) j1 jn,
    fun k2 h1 h2 => by omega, fun k2 h1 h2 j j1 jn => le_of_eq (c8 k2 j h2 j1 jn),
    fun k2 h1 h2 j j1 jn => c8 k2 j h2 j1 jn, fun a b => ?_⟩
  rw [c6]; exact hb a b

/-- The chain of predecessors from a potential below the sentinel ends at position 0 after
as many steps as the row says. -/
theorem LFDurInv.lfdur_chain {p : Params} {T : List Int} {K : Nat} {s : Split}
    (h : LFDurInv p T K s K) (hlim : LIM ≤ INF) : ∀ k2 : Nat, 1 ≤ k2 → k2 ≤ K → ∀ j,
    1 ≤ j → j ≤ p.nbClients → s.potential k2 j < INF →
    chain s.pred (fun k => k + 1) k2 j = 0
  | 0, h1, _, _, _, _, _ => by omega
  | 0 + 1, _, hk, j, j1, jn, hlt => by
    obtain ⟨f1, f2, _, _, f3⟩ := h.fin 1 (le_refl _) hk j j1 jn hlt
    simp only [Nat.sub_self] at f3
    show chain s.pred (fun k => k + 1) 0 (s.pred 1 j) = 0
    simp only [chain]
    by_contra hne
    have := h.row0 (s.pred 1 j) (Nat.pos_of_ne_zero hne) (by omega)
    linarith
  | (k + 1) + 1, _, hk, j, j1, jn, hlt => by
    obtain ⟨f1, f2, _, _, f3⟩ := h.fin (k + 1 + 1) (by omega) hk j j1 jn hlt
    simp only [Nat.add_sub_cancel] at f1 f3
    show chain s.pred (fun k => k + 1) (k + 1) (s.pred (k + 1 + 1) j) = 0
    exact LFDurInv.lfdur_chain h hlim (k + 1) (by omega) (by omega) _ (by omega) (by omega)
      (lt_of_lt_of_le f3 hlim)

end Split
namespace Split

theorem update_queue_keep (p : Params) (k : Nat) (sp2 : Split) (q : Trivial_Deque) (i : Nat)
    {P : Nat → Prop} (hq : q.All P) (hd : sp2.dominates p q.get_back i k = true) :
    (update_queue p k sp2 q i).All P := by
  unfold update_queue
  have hne : ¬ (sp2.dominates p q.get_back i k = false) := by rw [hd]; simp
  simp only [if_neg hne]
  obtain ⟨b1, b2, b3, b4⟩ := pop_front_loop_spec p sp2 k i q.size.toNat q hq.1
  refine ⟨by omega, fun t h1 h2 => ?_⟩
  rw [b2]
  exact hq.2 t (by omega) (by omega)

/-- At level 0 of `splitLF` the front 0 dominates every position: the positions `i >= 1`
hold the sentinel in row 0. -/
theorem dominates_level0 {p : Params} {T : List Int} {s : Split} (hP : Prepared p T s)
    (h0 : SmallL0 p T) (hz : s.potential 0 0 = 0) {i : Nat} (hi1 : 1 ≤ i)
    (hin : i < p.nbClients) (hinf : s.potential 0 i = INF) :
    s.dominates p 0 i 0 = true := by
  unfold dominates
  rw [decide_eq_true_iff, hinf, hz, hP.cli (i + 1) (by omega) (by omega),
    hP.cli (0 + 1) (by omega) (by omega), hP.dist (i + 1) (by omega), hP.dist (0 + 1) (by omega),
    hP.load i (by omega), hP.load 0 (by omega)]
  exact h0 i hin hi1

theorem LevelDq.leveldq_step {p : Params} {T : List Int} (hdur : p.isDurationConstraint = false)
    {s0 s : Split} {k i : Nat} (h : LevelDq p T s0 s k i) (hki : k + 1 ≤ i)
    (hin : i ≤ p.nbClients)
    (hL0 : k = 0 → SmallL0 p T ∧ s0.potential 0 0 = 0 ∧
      ∀ j, 1 ≤ j → j ≤ p.nbClients → s0.potential 0 j = INF)
    {q : Trivial_Deque} (hq : q.All (fun d => k ≤ d ∧ d < i ∧ (k = 0 → d = 0))) :
    LevelDq p T s0 (deque_step p k (k + 1) s q i).1 k (i + 1) ∧
    (deque_step p k (k + 1) s q i).2.All (fun d => k ≤ d ∧ d < i + 1 ∧ (k = 0 → d = 0)) := by
  obtain ⟨f1, f2, f3, f4, f5, f6, f7⟩ := write_front_fields p k (k + 1) s q i
  obtain ⟨g1, g2, g3⟩ := hq.front
  have hP2 : Prepared p T (write_front p k (k + 1) s q i) := h.prepared.of_fields f3 f4 f5 f6
  have hrowk : ∀ b, (write_front p k (k + 1) s q i).potential k b = s.potential k b := by
    intro b
    rw [f1, upd2_other _ _ _ _ _ _ (fun g => by omega)]
  have hL : LevelDq p T s0 (write_front p k (k + 1) s q i) k (i + 1) := by
    refine ⟨hP2, f7.trans h.maxv, fun a b hab => ?_, fun j j1 ji => ?_⟩
    · rw [f1, f2, upd2_other _ _ _ _ _ _ (fun g => by rcases hab with e | e | e <;> omega),
        upd2_other _ _ _ _ _ _ (fun g => by rcases hab with e | e | e <;> omega)]
      exact h.rows a b (by
        rcases hab with e | e | e
        · exact Or.inl e
        · exact Or.inr (Or.inl e)
        · exact Or.inr (Or.inr (by omega)))
    · rw [hrowk]
      by_cases e : j = i
      · subst e
        rw [f1, f2, upd2_same, upd2_same, propagate_eq h.prepared hdur g2 hin]
        exact ⟨g1, g2, g3, rfl⟩
      · obtain ⟨w0, w1, w2, w3⟩ := h.written j j1 (by omega)
        rw [f1, f2, upd2_other _ _ _ _ _ _ (fun g => e g.2),
          upd2_other _ _ _ _ _ _ (fun g => e g.2)]
        exact ⟨w0, w1, w2, w3⟩
  unfold deque_step
  generalize write_front p k (k + 1) s q i = sp2 at hP2 hrowk hL ⊢
  by_cases hi : i < p.nbClients
  · rw [if_pos hi]
    refine ⟨hL, ?_⟩
    by_cases hk : k = 0
    · obtain ⟨l1, l2, l3⟩ := hL0 hk
      have hback : q.get_back = 0 := hq.back.2.2 hk
      have hz : sp2.potential 0 0 = 0 := by
        have := hrowk 0
        rw [hk] at this
        rw [this, (h.rows 0 0 (Or.inl (by omega))).1]; exact l2
      have hinf : sp2.potential 0 i = INF := by
        have := hrowk i
        rw [hk] at this
        rw [this, (h.rows 0 i (Or.inl (by omega))).1]; exact l3 i (by omega) hin
      have hd := dominates_level0 hP2 l1 hz (by omega) hi hinf
      have hd2 : sp2.dominates p q.get_back i k = true := by rw [hk, hback]; exact hd
      exact (update_queue_keep p k sp2 q i hq hd2).mono (fun d hd => ⟨hd.1, by omega, hd.2.2⟩)
    · exact (update_queue_all p k sp2 q i hq).mono (fun d hd => by
        rcases hd with g | g
        · exact ⟨g.1, by omega, g.2.2⟩
        · exact ⟨by omega, by omega, fun e => absurd e hk⟩)
  · rw [if_neg hi]
    exact ⟨hL, hq.mono (fun d hd => ⟨hd.1, by omega, hd.2.2⟩)⟩

theorem LevelDq.leveldq_loop {p : Params} {T : List Int} (hdur : p.isDurationConstraint = false)
    {s0 : Split} {k : Nat}
    (hL0 : k = 0 → SmallL0 p T ∧ s0.potential 0 0 = 0 ∧
      ∀ j, 1 ≤ j → j ≤ p.nbClients → s0.potential 0 j = INF) :
    ∀ (m i : Nat) (s : Split) (q : Trivial_Deque), LevelDq p T s0 s k i → k + 1 ≤ i →
    i + m = p.nbClients + 1 → q.All (fun d => k ≤ d ∧ d < i ∧ (k = 0 → d = 0)) →
    LevelDq p T s0 (deque_loop p k (k + 1) m i s q) k (p.nbClients + 1)
  | 0, i, s, q, h, _, hm, _ => by
    have : i = p.nbClients + 1 := by omega
    subst this
    exact h
  | m + 1, i, s, q, h, hi, hm, hq => by
    unfold deque_loop
    have hs : 0 < q.size := by
      have := hq.1
      unfold Trivial_Deque.size
      omega
    rw [if_pos hs]
    obtain ⟨a1, a2⟩ := h.leveldq_step hdur hi (by omega) hL0 hq
    exact LevelDq.leveldq_loop hdur hL0 m (i + 1) _ _ a1 (by omega) (by omega) a2

theorem reset_all (k : Nat) :
    ((Trivial_Deque.create 0).reset k).All (fun d => k ≤ d ∧ d < k + 1 ∧ (k = 0 → d = 0)) := by
  refine ⟨le_refl _, fun t h1 h2 => ?_⟩
  have h3 : (0 : Int) ≤ t := h1
  have h4 : t ≤ (0 : Int) := h2
  have : t = 0 := by omega
  subst this
  simp only [Trivial_Deque.reset, upd_same]
  exact ⟨le_refl _, Nat.lt_succ_self _, fun e => e⟩

theorem LFDqInv.lfdq_level {p : Params} {T : List Int} (hdur : p.isDurationConstraint = false)
    (h0 : SmallL0 p T) {K k : Nat} {s : Split} (h : LFDqInv p T K s k) (hk : k < K) :
    LFDqInv p T K
      (deque_loop p k (k + 1) (p.nbClients - k) (k + 1) s ((Trivial_Deque.create 0).reset k))
      (k + 1) ∧
    (deque_loop p k (k + 1) (p.nbClients - k) (k + 1) s
      ((Trivial_Deque.create 0).reset k)).maxVehicles = s.maxVehicles := by
  by_cases hkn : k ≤ p.nbClients
  · have L := @LevelDq.leveldq_loop p T hdur s k (fun _ => ⟨h0, h.zero, h.row0⟩)
      (p.nbClients - k) (k + 1) s ((Trivial_Deque.create 0).reset k)
      ⟨h.prepared, rfl, fun _ _ _ => ⟨rfl, rfl⟩, fun j j1 j2 => by omega⟩ (le_refl _)
      (by omega) (reset_all k)
    refine ⟨⟨L.prepared, ?_, fun j j1 jn => ?_, fun k2 h1 h2 j j1 jn => ?_,
      fun k2 h1 h2 j j1 jn hc => ?_, fun a b => ?_⟩, L.maxv⟩
    · rw [(L.rows 0 0 (Or.inl (by omega))).1]; exact h.zero
    · rw [(L.rows 0 j (Or.inl (by omega))).1]; exact h.row0 j j1 jn
    · by_cases c : k2 = k + 1
      · subst c
        obtain ⟨w0, w1, w2, w3⟩ := L.written j j1 (by omega)
        simp only [Nat.add_sub_cancel]
        exact ⟨w0, w1, fun e => w2 (by omega), w3⟩
      · have r1 := L.rows k2 j (Or.inl c)
        obtain ⟨f1, f2, f3, f4⟩ := h.written k2 h1 (by omega) j j1 jn
        have r2 := L.rows (k2 - 1) (s.pred k2 j) (Or.inl (by omega))
        rw [r1.1, r1.2, r2.1]
        exact ⟨f1, f2, f3, f4⟩
    · by_cases c : k2 = k + 1
      · subst c
        rw [(L.rows (k + 1) j (Or.inr (Or.inl (by omega)))).1]
        exact h.cleared (k + 1) h1 h2 j j1 jn (Or.inr (by omega))
      · rw [(L.rows k2 j (Or.inl c)).1]
        exact h.cleared k2 h1 h2 j j1 jn (by omega)
    · by_cases c : a = k + 1 ∧ k + 1 ≤ b ∧ b ≤ p.nbClients
      · obtain ⟨c1, c2, c3⟩ := c
        subst c1
        exact le_of_lt (L.written b c2 (by omega)).2.1
      · rw [(L.rows a b (by omega)).2]; exact h.pred_le _ _
  · have e0 : p.nbClients - k = 0 := by omega
    rw [e0]
    have e1 : deque_loop p k (k + 1) 0 (k + 1) s ((Trivial_Deque.create 0).reset k) = s := rfl
    rw [e1]
    refine ⟨⟨h.prepared, h.zero, h.row0, fun k2 h1 h2 j j1 jn => ?_,
      fun k2 h1 h2 j j1 jn hc => ?_, h.pred_le⟩, rfl⟩
    · by_cases c : k2 = k + 1
      · omega
      · exact h.written k2 h1 (by omega) j j1 jn
    · by_cases c : k2 = k + 1
      · subst c
        exact h.cleared (k + 1) h1 h2 j j1 jn (Or.inr (by omega))
      · exact h.cleared k2 h1 h2 j j1 jn (by omega)

end Split
namespace Split

theorem LFDqInv.lfdq_fold {p : Params} {T : List Int} (hdur : p.isDurationConstraint = false)
    (h0 : SmallL0 p T) {K : Nat} {s : Split} (h : LFDqInv p T K s 0) : ∀ k : Nat, k ≤ K →
    LFDqInv p T K ((List.range k).foldl
      (fun (s : Split) (k : Nat) =>
        deque_loop p k (k + 1) (p.nbClients - k) (k + 1) s ((Trivial_Deque.create 0).reset k))
      s) k ∧
    ((List.range k).foldl
      (fun (s : Split) (k : Nat) =>
        deque_loop p k (k + 1) (p.nbClients - k) (k + 1) s ((Trivial_Deque.create 0).reset k))
      s).maxVehicles = s.maxVehicles
  | 0, _ => ⟨h, rfl⟩
  | k + 1, hk => by
    simp only [List.range_succ, List.foldl_append, List.foldl_cons, List.foldl_nil]
    obtain ⟨a1, a2⟩ := LFDqInv.lfdq_fold hdur h0 h k (by omega)
    obtain ⟨b1, b2⟩ := a1.lfdq_level hdur h0 (by omega)
    exact ⟨b1, b2.trans a2⟩

theorem LFDqInv.lfdq_init {p : Params} {T : List Int} {sp : Split} (hP : Prepared p T sp)
    (hb : ∀ a b, sp.pred a b ≤ b) (K : Nat) :
    LFDqInv p T K ((List.range (K + 1)).foldl (fun (s : Split) (k : Nat) => clear_row p k s)
      { sp with potential := upd2 sp.potential 0 0 0 }) 0 := by
  obtain ⟨c1, c2, c3, c4, c5, c6, c7, c8⟩ := lf_init_spec p K sp
  refine ⟨hP.of_fields c1 c2 c3 c4, c7, fun j j1 jn => c8 0 j (Nat.zero_le _) j1 jn,
    fun k2 h1 h2 => by omega, fun k2 h1 h2 j j1 jn _ => c8 k2 j h2 j1 jn, fun a b => ?_⟩
  rw [c6]; exact hb a b

/-- In the linear algorithm the chain of predecessors from a position that is at least the
row index ends at position 0 after as many steps as the row says. -/
theorem LFDqInv.lfdq_chain {p : Params} {T : List Int} {K : Nat} {s : Split}
    (h : LFDqInv p T K s K) : ∀ k2 : Nat, 1 ≤ k2 → k2 ≤ K → ∀ j, k2 ≤ j → j ≤ p.nbClients →
    chain s.pred (fun k => k + 1) k2 j = 0
  | 0, h1, _, _, _, _ => by omega
  | 0 + 1, _, hk, j, j1, jn => by
    obtain ⟨_, _, f3, _⟩ := h.written 1 (le_refl _) hk j j1 jn
    show chain s.pred (fun k => k + 1) 0 (s.pred 1 j) = 0
    simp only [chain]
    exact f3 rfl
  | (k + 1) + 1, _, hk, j, j1, jn => by
    obtain ⟨f1, f2, _, _⟩ := h.written (k + 1 + 1) (by omega) hk j j1 jn
    simp only [Nat.add_sub_cancel] at f1
    show chain s.pred (fun k => k + 1) (k + 1) (s.pred (k + 1 + 1) j) = 0
    exact LFDqInv.lfdq_chain h (k + 1) (by omega) (by omega) _ f1 (by omega)

/-- The main algorithm of `splitLF`, in both branches: the vectors of the tour and
`maxVehicles` are kept, every predecessor is at most its position, row 0 holds the sentinel
at the positions of the tour, and from every potential of the last position that is below
the sentinel the chain of predecessors ends at position 0. -/
theorem lf_potentials_spec {p : Params} {T : List Int} {sp : Split} (hP : Prepared p T sp)
    (hb : ∀ a b, sp.pred a b ≤ b) (hlim : LIM ≤ INF)
    (h0 : p.isDurationConstraint = false → SmallL0 p T) (K : Nat) :
    Prepared p T (lf_potentials p K sp) ∧
    (lf_potentials p K sp).maxVehicles = sp.maxVehicles ∧
    (∀ a b, (lf_potentials p K sp).pred a b ≤ b) ∧
    (∀ j, 1 ≤ j → j ≤ p.nbClients → (lf_potentials p K sp).potential 0 j = INF) ∧
    (∀ k2, 1 ≤ k2 → k2 ≤ K → 1 ≤ p.nbClients →
      (lf_potentials p K sp).potential k2 p.nbClients < INF →
      chain (lf_potentials p K sp).pred (fun k => k + 1) k2 p.nbClients = 0) := by
  unfold lf_potentials
  simp only
  by_cases hdur : p.isDurationConstraint = true
  · rw [if_pos hdur]
    obtain ⟨a1, a2⟩ := (LFDurInv.lfdur_init hP hb K).lfdur_fold hdur K (le_refl _)
    obtain ⟨c1, c2, c3, c4, c5, c6, c7, c8⟩ := lf_init_spec p K sp
    exact ⟨a1.prepared, a2.trans c5, a1.pred_le, a1.row0,
      fun k2 h1 h2 hn hlt => a1.lfdur_chain hlim k2 h1 h2 _ hn (le_refl _) hlt⟩
  · have hdur2 : p.isDurationConstraint = false := by simpa using hdur
    rw [if_neg hdur]
    obtain ⟨a1, a2⟩ := (LFDqInv.lfdq_init hP hb K).lfdq_fold hdur2 (h0 hdur2) K (le_refl _)
    obtain ⟨c1, c2, c3, c4, c5, c6, c7, c8⟩ := lf_init_spec p K sp
    refine ⟨a1.prepared, a2.trans c5, a1.pred_le, a1.row0, fun k2 h1 h2 hn hlt => ?_⟩
    refine a1.lfdq_chain k2 h1 h2 _ ?_ (le_refl _)
    by_contra hc
    have := a1.cleared k2 h1 h2 p.nbClients hn (le_refl _) (Or.inl (by omega))
    linarith

theorem best_routes_fold (p : Params) (sp : Split) (K : Nat) : ∀ m : Nat, m + 1 ≤ K →
    let b := (List.range m).foldl
      (fun (b : ℚ × Nat) (m : Nat) =>
        if sp.potential (m + 1) p.nbClients < b.1 then (sp.potential (m + 1) p.nbClients, m + 1)
        else b)
      (sp.potential K p.nbClients, K)
    b.1 = sp.potential b.2 p.nbClients ∧ b.1 ≤ sp.potential K p.nbClients ∧
    (b.2 = K ∨ (1 ≤ b.2 ∧ b.2 < K)) := by
  intro m
  induction m with
  | zero => intro _; exact ⟨rfl, le_refl _, Or.inl rfl⟩
  | succ m ih =>
    intro hm
    obtain ⟨i1, i2, i3⟩ := ih (by omega)
    simp only [List.range_succ, List.foldl_append, List.foldl_cons, List.foldl_nil]
    split_ifs with c
    · exact ⟨rfl, by simp only; linarith, Or.inr ⟨by simp, by simp only; omega⟩⟩
    · exact ⟨i1, i2, i3⟩

/-- The number of routes chosen by `splitLF`. -/
theorem best_routes_spec (p : Params) (sp : Split) (K : Nat) :
    sp.potential (best_routes p sp K).2 p.nbClients ≤ sp.potential K p.nbClients ∧
    ((best_routes p sp K).2 = K ∨ (1 ≤ (best_routes p sp K).2 ∧ (best_routes p sp K).2 < K)) := by
  unfold best_routes
  by_cases hK : K = 0
  · subst hK
    exact ⟨le_refl _, Or.inl rfl⟩
  · obtain ⟨i1, i2, i3⟩ := best_routes_fold p sp K (K - 1) (by omega)
    exact ⟨by rw [← i1]; exact i2, i3⟩

/-- Method `splitLF` either throws or leaves routes that, in the order of their indices,
make up the tour, and returns `true`. -/
theorem splitLF_spec {p : Params} {T : List Int} {sp : Split} (hP : Prepared p T sp)
    (hb : ∀ a b, sp.pred a b ≤ b) (hlim : LIM < INF)
    (h0 : p.isDurationConstraint = false → SmallL0 p T) (hn : 1 ≤ p.nbClients)
    (hT : T.length = p.nbClients) (hK : sp.maxVehicles.toNat ≤ p.nbVehicles)
    (R : Nat → List Int) {r : Bool × Split × Individual}
    (hr : splitLF p sp ⟨T, R⟩ = some r) :
    r.1 = true ∧ r.2.1 = lf_potentials p sp.maxVehicles.toNat sp ∧ r.2.2.chromT = T ∧
    ((List.range p.nbVehicles).map r.2.2.chromR).flatten = T := by
  obtain ⟨a1, a2, a3, a4, a5⟩ := lf_potentials_spec hP hb (le_of_lt hlim) h0 sp.maxVehicles.toNat
  unfold splitLF at hr
  simp only at hr
  by_cases c : (lf_potentials p sp.maxVehicles.toNat sp).potential sp.maxVehicles.toNat
      p.nbClients > LIM
  · rw [if_pos c] at hr
    cases hr
  · rw [if_neg c] at hr
    obtain ⟨b1, b2⟩ := best_routes_spec p (lf_potentials p sp.maxVehicles.toNat sp)
      sp.maxVehicles.toNat
    have hfin : (lf_potentials p sp.maxVehicles.toNat sp).potential
        (best_routes p (lf_potentials p sp.maxVehicles.toNat sp) sp.maxVehicles.toNat).2
        p.nbClients < INF := by linarith [not_lt.1 c]
    have hpos : 1 ≤ (best_routes p (lf_potentials p sp.maxVehicles.toNat sp)
        sp.maxVehicles.toNat).2 := by
      by_contra hc
      have e0 : (best_routes p (lf_potentials p sp.maxVehicles.toNat sp)
        sp.maxVehicles.toNat).2 = 0 := by omega
      rw [e0] at hfin
      have := a4 p.nbClients hn (le_refl _)
      linarith
    have hle : (best_routes p (lf_potentials p sp.maxVehicles.toNat sp)
        sp.maxVehicles.toNat).2 ≤ sp.maxVehicles.toNat := by omega
    have hch := a5 _ hpos hle hn hfin
    have hend := fill_end T (lf_potentials p sp.maxVehicles.toNat sp).pred (fun k => k + 1)
      (best_routes p (lf_potentials p sp.maxVehicles.toNat sp) sp.maxVehicles.toNat).2
      (clear_routes p
        (best_routes p (lf_potentials p sp.maxVehicles.toNat sp) sp.maxVehicles.toNat).2 R)
      p.nbClients
    rw [hch] at hend
    have hj := routes_join p T hT (lf_potentials p sp.maxVehicles.toNat sp).pred
      (fun k => k + 1) a3 _ (le_trans hle hK) R hend
    simp only [Option.some.injEq] at hr
    rw [← hr]
    refine ⟨?_, rfl, rfl, hj⟩
    simp only [decide_eq_true_eq]
    exact hend

end Split
namespace Split

theorem chain_start (pred : Nat → Nat → Nat) (row : Nat → Nat) (hle : ∀ k j, pred k j ≤ j) :
    ∀ K : Nat, chain pred row K 0 = 0
  | 0 => rfl
  | K + 1 => by
    simp only [chain]
    have := hle (row K) 0
    have e : pred (row K) 0 = 0 := by omega
    rw [e]
    exact chain_start pred row hle K

/-- The main algorithm of `splitSimple`, in both branches: the vectors of the tour and
`maxVehicles` are kept, and every predecessor is at most its position. -/
theorem simple_potentials_spec {p : Params} {T : List Int} {sp : Split} (hP : Prepared p T sp)
    (hb : ∀ a b, sp.pred a b ≤ b) :
    Prepared p T (simple_potentials p sp) ∧
    (simple_potentials p sp).maxVehicles = sp.maxVehicles ∧
    (∀ a b, (simple_potentials p sp).pred a b ≤ b) := by
  by_cases hdur : p.isDurationConstraint = true
  · have h := bellman_final hdur hP
    exact ⟨h.prepared, h.maxv, h.pred_le hb⟩
  · have hdur2 : p.isDurationConstraint = false := by simpa using hdur
    have h := deque_final hdur2 hP
    refine ⟨h.prepared, h.maxv, fun a b => ?_⟩
    by_cases c : a ≠ 0 ∨ p.nbClients < b
    · rw [(h.rows a b c).2]; exact hb a b
    · have ha : a = 0 := by
        by_contra g
        exact c (Or.inl g)
      have hbn : b ≤ p.nbClients := by
        by_contra g
        exact c (Or.inr (by omega))
      subst ha
      by_cases b0 : b = 0
      · subst b0
        rw [h.pred_zero]; exact hb 0 0
      · exact le_of_lt (h.written b (by omega) (by omega)).1

/-- Method `splitSimple` either throws or returns `true` with routes that, in the order of
their indices, make up the tour, or returns `false`; it returns `false` only for a tour
that is not empty. -/
theorem splitSimple_spec {p : Params} {T : List Int} {sp : Split} (hP : Prepared p T sp)
    (hb : ∀ a b, sp.pred a b ≤ b) (hT : T.length = p.nbClients)
    (hK : sp.maxVehicles.toNat ≤ p.nbVehicles) (R : Nat → List Int)
    {r : Bool × Split × Individual} (hr : splitSimple p sp ⟨T, R⟩ = some r) :
    r.2.1 = simple_potentials p sp ∧ r.2.2.chromT = T ∧
    (r.1 = true → ((List.range p.nbVehicles).map r.2.2.chromR).flatten = T) ∧
    (r.1 = false → 1 ≤ p.nbClients) := by
  obtain ⟨a1, a2, a3⟩ := simple_potentials_spec hP hb
  unfold splitSimple at hr
  simp only at hr
  by_cases c : (simple_potentials p sp).potential 0 p.nbClients > LIM
  · rw [if_pos c] at hr
    cases hr
  · rw [if_neg c] at hr
    simp only [Option.some.injEq] at hr
    rw [← hr]
    rw [a2]
    have hend := fill_end T (simple_potentials p sp).pred (fun _ => 0) sp.maxVehicles.toNat
      (clear_routes p sp.maxVehicles.toNat R) p.nbClients
    refine ⟨rfl, rfl, fun h => ?_, fun h => ?_⟩
    · simp only [decide_eq_true_eq] at h
      exact routes_join p T hT _ _ a3 _ hK R h
    · simp only [decide_eq_false_iff_not] at h
      by_contra hc
      have e0 : p.nbClients = 0 := by omega
      rw [hend, e0] at h
      exact h (chain_start _ _ a3 _)

theorem LIM_lt_INF : LIM < INF := by
  unfold LIM INF
  norm_num

/-- Method `generalSplit`, when it does not throw, leaves routes that, in the order of their
indices, make up the tour. -/
theorem generalSplit_spec {p : Params} {T : List Int} {sp : Split} (hbase : Base sp)
    (hT : T.length = p.nbClients)
    (h0 : p.isDurationConstraint = false → SmallL0 p T) (nbMaxVehicles : Int)
    (hK : ∀ lower, ceil_div p.totalDemand p.vehicleCapacity = some lower →
      (max nbMaxVehicles lower).toNat ≤ p.nbVehicles)
    (R : Nat → List Int) {r : Split × Individual}
    (hr : generalSplit p sp ⟨T, R⟩ nbMaxVehicles = some r) :
    r.2.chromT = T ∧ ((List.range p.nbVehicles).map r.2.chromR).flatten = T := by
  have hlim := LIM_lt_INF
  unfold generalSplit at hr
  cases hc : ceil_div p.totalDemand p.vehicleCapacity with
  | none => rw [hc] at hr; cases hr
  | some lower =>
  rw [hc] at hr
  simp only at hr
  have hK := hK lower hc
  generalize hsp1 : ({ sp with maxVehicles := max nbMaxVehicles lower } : Split) = sp1 at hr
  have hb1 : Base sp1 := by
    rw [← hsp1]
    exact ⟨hbase.dnext0, hbase.load0, hbase.serv0, hbase.dist0, hbase.pred_le⟩
  have hm1 : sp1.maxVehicles = max nbMaxVehicles lower := by
    rw [← hsp1]
  obtain ⟨q1, q2, q3, q4, q5⟩ := prepare_spec p T sp1 hb1
  have hK2 : (prepare p T sp1).maxVehicles.toNat ≤ p.nbVehicles := by rw [q5, hm1]; exact hK
  cases h1 : splitSimple p (prepare p T sp1) ⟨T, R⟩ with
  | none => rw [h1] at hr; cases hr
  | some r1 =>
    rw [h1] at hr
    obtain ⟨ok, sp3, indiv3⟩ := r1
    obtain ⟨s1, s2, s3, s4⟩ := splitSimple_spec q1 q2.pred_le hT hK2 R h1
    simp only at hr s1 s2 s3 s4
    by_cases hok : ok = true
    · rw [if_pos hok] at hr
      simp only [Option.some.injEq] at hr
      rw [← hr]
      exact ⟨s2, s3 hok⟩
    · rw [if_neg hok] at hr
      have hok2 : ok = false := by simpa using hok
      obtain ⟨t1, t2, t3⟩ := simple_potentials_spec q1 q2.pred_le
      rw [← s1] at t1 t2 t3
      have hK3 : sp3.maxVehicles.toNat ≤ p.nbVehicles := by rw [t2]; exact hK2
      obtain ⟨T3, R3⟩ := indiv3
      simp only at s2
      subst s2
      cases h2 : splitLF p sp3 ⟨T3, R3⟩ with
      | none => rw [h2] at hr; cases hr
      | some r2 =>
        rw [h2] at hr
        obtain ⟨u1, u2, u3, u4⟩ := splitLF_spec t1 t3 hlim h0 (s4 hok2) hT hK3 R3 h2
        obtain ⟨ok2, sp4, indiv4⟩ := r2
        simp only [Option.some.injEq] at hr
        rw [← hr]
        exact ⟨u3, u4⟩

end Split
theorem binary64_whole {x : ℚ} (hw : ∃ z : Int, x = (z : ℚ)) (hb : |x| ≤ 2 ^ 53) :
    binary64 x = x := by
  obtain ⟨z, rfl⟩ := hw
  refine binary64_int z ?_
  have : |((z : Int) : ℚ)| = ((|z| : Int) : ℚ) := by simp
  rw [this] at hb
  exact_mod_cast hb

theorem whole_sum (f : Int → ℚ) (hf : ∀ c, ∃ d : Nat, f c = (d : ℚ)) : ∀ l : List Int,
    ∃ z : Int, (l.map f).sum = (z : ℚ) ∧ 0 ≤ z
  | [] => ⟨0, by simp, le_refl _⟩
  | c :: l => by
    obtain ⟨z, hz, hz0⟩ := whole_sum f hf l
    obtain ⟨d, hd⟩ := hf c
    refine ⟨(d : Int) + z, ?_, by omega⟩
    simp only [List.map_cons, List.sum_cons, hz, hd]
    push_cast
    rfl

theorem sum_take_le (f : Int → ℚ) (hf : ∀ c, 0 ≤ f c) (l : List Int) (j : Nat) :
    ((l.take j).map f).sum ≤ (l.map f).sum := by
  conv_rhs => rw [← List.take_append_drop j l]
  rw [List.map_append, List.sum_append]
  have : 0 ≤ ((l.drop j).map f).sum := by
    apply List.sum_nonneg
    intro x hx
    rw [List.mem_map] at hx
    obtain ⟨c, _, rfl⟩ := hx
    exact hf c
  linarith

theorem sum_take_mono (f : Int → ℚ) (hf : ∀ c, 0 ≤ f c) (l : List Int) {i j : Nat}
    (h : i ≤ j) : ((l.take i).map f).sum ≤ ((l.take j).map f).sum := by
  have := sum_take_le f hf (l.take j) i
  rwa [List.take_take, Nat.min_eq_left h] at this

namespace Split

/-- With whole demands that are not negative and sum to at most `2 ^ 53` over the tour, the
sums of demands of the source are exact. -/
theorem loadTo_take (p : Params) (T : List Int) (hdem : ∀ c, ∃ d : Nat, p.demand c = (d : ℚ))
    (hsum : (T.map p.demand).sum ≤ 2 ^ 53) : ∀ j : Nat, j ≤ T.length →
    loadTo p T j = ((T.take j).map p.demand).sum
  | 0, _ => by simp [loadTo]
  | j + 1, hj => by
    have ih := loadTo_take p T hdem hsum j (by omega)
    have hlt : j < T.length := by omega
    have hnn : ∀ c, 0 ≤ p.demand c := fun c => by
      obtain ⟨d, hd⟩ := hdem c
      rw [hd]
      exact Nat.cast_nonneg d
    have e : ((T.take (j + 1)).map p.demand).sum =
        ((T.take j).map p.demand).sum + p.demand (T.getD j 0) := by
      rw [List.take_succ, List.getElem?_eq_getElem hlt, List.getD_eq_getElem _ _ hlt,
        Option.toList_some, List.map_append, List.sum_append]
      simp only [List.map_cons, List.map_nil, List.sum_cons, List.sum_nil, add_zero]
    show fadd (loadTo p T j) (p.demand (T.getD j 0)) = _
    rw [ih, e]
    unfold fadd
    rw [← e]
    obtain ⟨z, hz, hz0⟩ := whole_sum p.demand hdem (T.take (j + 1))
    refine binary64_whole ⟨z, hz⟩ ?_
    have h1 := sum_take_le p.demand hnn T (j + 1)
    rw [abs_of_nonneg (by rw [hz]; exact_mod_cast hz0)]
    linarith

theorem loadB_exact (p : Params) (T : List Int) (hdem : ∀ c, ∃ d : Nat, p.demand c = (d : ℚ))
    (hsum : (T.map p.demand).sum ≤ 2 ^ 53) (i : Nat) : ∀ d : Nat, i + d ≤ T.length →
    loadB p T i (i + d) = loadTo p T (i + d) - loadTo p T i
  | 0, _ => by simp [loadB_self]
  | d + 1, hd => by
    have ih := loadB_exact p T hdem hsum i d (by omega)
    have hnn : ∀ c, 0 ≤ p.demand c := fun c => by
      obtain ⟨d, hd⟩ := hdem c
      rw [hd]
      exact Nat.cast_nonneg d
    have e1 : i + (d + 1) = (i + d) + 1 := by omega
    rw [e1, loadB_succ p T (show i ≤ i + d by omega), ih]
    have e2 := loadTo_take p T hdem hsum (i + d + 1) (by omega)
    have e3 := loadTo_take p T hdem hsum (i + d) (by omega)
    have e4 := loadTo_take p T hdem hsum i (by omega)
    have e5 : loadTo p T (i + d + 1) = loadTo p T (i + d) + p.demand (cust T (i + d + 1)) := by
      rw [e2, e3]
      have hlt : i + d < T.length := by omega
      rw [List.take_succ, List.getElem?_eq_getElem hlt, Option.toList_some, List.map_append,
        List.sum_append]
      simp only [List.map_cons, List.map_nil, List.sum_cons, List.sum_nil, add_zero, cust,
        Nat.add_sub_cancel, List.getD_eq_getElem _ _ hlt]
    unfold fadd
    have e6 : loadTo p T (i + d) - loadTo p T i + p.demand (cust T (i + d + 1)) =
        loadTo p T (i + d + 1) - loadTo p T i := by rw [e5]; ring
    rw [e6]
    obtain ⟨z1, hz1, _⟩ := whole_sum p.demand hdem (T.take (i + d + 1))
    obtain ⟨z2, hz2, _⟩ := whole_sum p.demand hdem (T.take i)
    have m1 := sum_take_mono p.demand hnn T (show i ≤ i + d + 1 by omega)
    have m2 := sum_take_le p.demand hnn T (i + d + 1)
    have m3 : 0 ≤ ((T.take i).map p.demand).sum := by rw [hz2]; exact_mod_cast (by assumption)
    refine binary64_whole ⟨z1 - z2, ?_⟩ ?_
    · rw [e2, e4, hz1, hz2]
      push_cast
      rfl
    · rw [e2, e4, abs_of_nonneg (by linarith)]
      linarith

theorem loadTo_mono_take (p : Params) (T : List Int)
    (hdem : ∀ c, ∃ d : Nat, p.demand c = (d : ℚ)) (hsum : (T.map p.demand).sum ≤ 2 ^ 53)
    {a b : Nat} (hab : a ≤ b) (hb : b ≤ T.length) : loadTo p T a ≤ loadTo p T b := by
  have hnn : ∀ c, 0 ≤ p.demand c := fun c => by
    obtain ⟨d, hd⟩ := hdem c
    rw [hd]
    exact Nat.cast_nonneg d
  rw [loadTo_take p T hdem hsum a (by omega), loadTo_take p T hdem hsum b hb]
  exact sum_take_mono p.demand hnn T hab

theorem fmul_half (q : Nat) (hq : (q : ℚ) < 2 ^ 51) : fmul (3 / 2) (q : ℚ) = 3 / 2 * q := by
  unfold fmul
  have h := binary64_dyadic (3 * (q : Int)) (-1) (by
    have : (q : Int) < 2 ^ 51 := by exact_mod_cast hq
    rw [abs_of_nonneg (by omega)]
    omega) (by norm_num)
  have e : ((3 * (q : Int) : Int) : ℚ) * pow2 (-1) = 3 / 2 * (q : ℚ) := by
    rw [pow2_eq]
    push_cast
    norm_num
    ring
  rw [e] at h
  exact h

end Split
namespace Split

theorem ceil_div_some {a b : ℚ} (hb : 0 < b) {lower : Int} (h : ceil_div a b = some lower) :
    lower = ⌈binary64 (a / b)⌉ := by
  have e : Dbl.div (Dbl.fin a) (Dbl.fin b) = Dbl.round (a / b) := by
    simp only [Dbl.div, if_neg (ne_of_gt hb)]
  unfold ceil_div at h
  rw [e] at h
  unfold Dbl.round at h
  split_ifs at h with c1 c2
  · simp [Dbl.ceil, Dbl.toInt] at h
  · simp [Dbl.ceil, Dbl.toInt] at h
  · simp only [Dbl.ceil, Dbl.toInt] at h
    simp only [Int.floor_intCast, Int.ceil_intCast, ite_self] at h
    split_ifs at h with c3
    simp only [Option.some.injEq] at h
    exact h.symm

/-- A power of two that is at least `q` and below `2 * q`. -/
theorem pow_clog_bounds (q : Nat) (hq : 1 ≤ q) :
    q ≤ 2 ^ Nat.clog 2 q ∧ 2 ^ Nat.clog 2 q < 2 * q := by
  refine ⟨Nat.le_pow_clog (by norm_num) q, ?_⟩
  by_cases h1 : q = 1
  · subst h1
    simp
  · have h2 : 1 < q := by omega
    have := Nat.pow_pred_clog_lt_self (show 1 < 2 by norm_num) h2
    have hpos : 0 < Nat.clog 2 q := Nat.clog_pos (by norm_num) h2
    have e : Nat.clog 2 q = (Nat.clog 2 q).pred + 1 := by
      rw [Nat.pred_eq_sub_one]
      omega
    rw [e, pow_succ]
    omega

/-- The quotient of two whole numbers below `2 ^ 51`, rounded to the type `double` and
then up to a whole number, is at least the exact quotient. -/
theorem ceil_quotient (td q : Nat) (hq : 1 ≤ q) (htd : td < 2 ^ 51) (hq51 : q < 2 ^ 51) :
    (td : ℚ) ≤ (⌈binary64 ((td : ℚ) / (q : ℚ))⌉ : ℚ) * (q : ℚ) := by
  have hqpos : (0 : ℚ) < (q : ℚ) := by exact_mod_cast hq
  by_cases h0 : td = 0
  · subst h0
    simp [binary64_zero]
  have hx : ((⌈(td : ℚ) / (q : ℚ)⌉ - 1 : Int) : ℚ) < (td : ℚ) / (q : ℚ) :=
    Int.lt_ceil.1 (by omega)
  have hc0 : 0 ≤ ⌈(td : ℚ) / (q : ℚ)⌉ - 1 := by
    have : (0 : Int) < ⌈(td : ℚ) / (q : ℚ)⌉ := by
      rw [Int.lt_ceil]
      have : (0 : ℚ) < (td : ℚ) := by exact_mod_cast Nat.pos_of_ne_zero h0
      simp only [Int.cast_zero]
      positivity
    omega
  have hup : (td : ℚ) / (q : ℚ) ≤ ((⌈(td : ℚ) / (q : ℚ)⌉ - 1 : Int) : ℚ) + 1 := by
    push_cast
    linarith [Int.le_ceil ((td : ℚ) / (q : ℚ))]
  generalize ⌈(td : ℚ) / (q : ℚ)⌉ - 1 = c at hx hc0 hup
  have h1 : (c : ℚ) * (q : ℚ) < (td : ℚ) := by
    rwa [lt_div_iff₀ hqpos] at hx
  have h2 : c * (q : Int) < (td : Int) := by exact_mod_cast h1
  have h3 : c * (q : Int) + 1 ≤ (td : Int) := by omega
  obtain ⟨j1, j2⟩ := pow_clog_bounds q hq
  generalize Nat.clog 2 q = j at j1 j2
  have hj : j ≤ 51 := by
    by_contra hc
    have : 2 ^ 52 ≤ 2 ^ j := Nat.pow_le_pow_right (by norm_num) (by omega)
    omega
  have j1z : (q : Int) ≤ 2 ^ j := by exact_mod_cast j1
  have j2z : (2 : Int) ^ j < 2 * (q : Int) := by exact_mod_cast j2
  have hm : |c * 2 ^ j + 1| < (2 : Int) ^ 53 := by
    have hp : (0 : Int) ≤ c * 2 ^ j := mul_nonneg hc0 (by positivity)
    rw [abs_of_nonneg (by omega)]
    have : c * 2 ^ j ≤ c * (2 * (q : Int)) := mul_le_mul_of_nonneg_left (le_of_lt j2z) hc0
    have htd2 : (td : Int) < 2 ^ 51 := by exact_mod_cast htd
    nlinarith
  have hd := binary64_dyadic (c * 2 ^ j + 1) (-(j : Int)) hm (by omega)
  have e : ((c * 2 ^ j + 1 : Int) : ℚ) * pow2 (-(j : Int)) = (c : ℚ) + 1 / 2 ^ j := by
    rw [pow2_eq, zpow_neg, zpow_natCast]
    push_cast
    field_simp
  rw [e] at hd
  have hle : (c : ℚ) + 1 / 2 ^ j ≤ (td : ℚ) / (q : ℚ) := by
    rw [le_div_iff₀ hqpos]
    have h4 : (c : ℚ) * (q : ℚ) + 1 ≤ (td : ℚ) := by exact_mod_cast h3
    have h5 : (1 : ℚ) / 2 ^ j * (q : ℚ) ≤ 1 := by
      rw [div_mul_eq_mul_div, one_mul, div_le_one (by positivity)]
      exact_mod_cast j1
    linarith
  have hge := binary64_ge_of_ge hd hle
  have hlt : ((c : Int) : ℚ) < binary64 ((td : ℚ) / (q : ℚ)) := by
    have : (0 : ℚ) < 1 / 2 ^ j := by positivity
    linarith
  have hceil : c + 1 ≤ ⌈binary64 ((td : ℚ) / (q : ℚ))⌉ := Int.lt_ceil.2 hlt
  have h6 : ((c + 1 : Int) : ℚ) ≤ (⌈binary64 ((td : ℚ) / (q : ℚ))⌉ : ℚ) := by exact_mod_cast hceil
  push_cast at h6
  have h7 : (td : ℚ) / (q : ℚ) ≤ (⌈binary64 ((td : ℚ) / (q : ℚ))⌉ : ℚ) := by linarith
  rwa [div_le_iff₀ hqpos] at h7

end Split
namespace Split

theorem propagateFrom_mono (p : Params) (T : List Int) {x y : ℚ} (h : x ≤ y) (i j : Nat) :
    propagateFrom p T x i j ≤ propagateFrom p T y i j := by
  unfold propagateFrom
  exact fadd_mono_left _ (fadd_mono_left _ (fadd_mono_left _ (fsub_mono_left _
    (fadd_mono_left _ h))))

theorem extend_dur {p : Params} (T : List Int) (hdur : p.isDurationConstraint = true) (x : ℚ)
    (a b : Nat) : extend p T x a b = fadd x (routeCost p T a b) := by
  unfold extend
  rw [if_pos hdur]

theorem extend_lin {p : Params} (T : List Int) (hdur : p.isDurationConstraint = false) (x : ℚ)
    (a b : Nat) : extend p T x a b = propagateFrom p T x a b := by
  unfold extend
  rw [hdur]
  simp

theorem singlesTo_le {p : Params} {T : List Int} (hdur : p.isDurationConstraint = true) (M : ℚ)
    (hM : ∀ k : Nat, k < p.nbClients → ∀ b, b ≤ p.nbClients → ∀ a, a < b →
      extend p T ((k : ℚ) * M) a b ≤ ((k : ℚ) + 1) * M) :
    ∀ j : Nat, j ≤ p.nbClients → singlesTo p T j ≤ (j : ℚ) * M
  | 0, _ => by simp [singlesTo]
  | j + 1, hj => by
    have h1 := singlesTo_le hdur M hM j (by omega)
    have h2 := hM j (by omega) (j + 1) hj j (Nat.lt_succ_self _)
    rw [extend_dur T hdur] at h2
    simp only [singlesTo]
    push_cast
    exact le_trans (fadd_mono_left _ h1) h2

theorem DequeInv.bounded {p : Params} {T : List Int} {s0 s : Split} {i : Nat}
    (h : DequeInv p T s0 s i) (hdur : p.isDurationConstraint = false) (M : ℚ) (hM0 : 0 ≤ M)
    (hM : ∀ k : Nat, k < p.nbClients → ∀ b, b ≤ p.nbClients → ∀ a, a < b →
      extend p T ((k : ℚ) * M) a b ≤ ((k : ℚ) + 1) * M) :
    ∀ j : Nat, j < i → j ≤ p.nbClients → s.potential 0 j ≤ (j : ℚ) * M := by
  intro j
  induction j using Nat.strong_induction_on with
  | _ j ih =>
    intro hj hjn
    by_cases j0 : j = 0
    · subst j0
      rw [h.zero]
      simp
    · obtain ⟨w1, w2⟩ := h.written j (by omega) hj
      rw [w2]
      have a1 := ih _ w1 (by omega) (by omega)
      have a2 := hM (s.pred 0 j) (by omega) j hjn _ w1
      rw [extend_lin T hdur] at a2
      have a3 : ((s.pred 0 j : Nat) : ℚ) + 1 ≤ (j : ℚ) := by exact_mod_cast w1
      have a4 := mul_le_mul_of_nonneg_right a3 hM0
      exact le_trans (propagateFrom_mono p T a1 _ _) (le_trans a2 a4)

theorem chain_le (pred : Nat → Nat → Nat) (row : Nat → Nat) (N : Nat)
    (hlt : ∀ k j, 1 ≤ j → j ≤ N → pred (row k) j < j) (hle : ∀ k j, pred k j ≤ j) :
    ∀ (K e : Nat), e ≤ N → chain pred row K e ≤ e - K
  | 0, e, _ => le_refl _
  | K + 1, e, he => by
    simp only [chain]
    by_cases e0 : e = 0
    · subst e0
      have := hle (row K) 0
      have := chain_le pred row N hlt hle K (pred (row K) 0) (by omega)
      omega
    · have := hlt K e (by omega) he
      have := chain_le pred row N hlt hle K (pred (row K) e) (by omega)
      omega

theorem LFDqInv.bounded_rows {p : Params} {T : List Int} {K k : Nat} {s : Split}
    (h : LFDqInv p T K s k) (hdur : p.isDurationConstraint = false) (M : ℚ) (hM0 : 0 ≤ M)
    (hM : ∀ k : Nat, k < p.nbClients → ∀ b, b ≤ p.nbClients → ∀ a, a < b →
      extend p T ((k : ℚ) * M) a b ≤ ((k : ℚ) + 1) * M) :
    ∀ k2 : Nat, k2 + 1 ≤ k → ∀ j, k2 + 1 ≤ j → j ≤ p.nbClients →
      s.potential (k2 + 1) j ≤ ((k2 + 1 : Nat) : ℚ) * M
  | 0, hk, j, hj, hjn => by
    obtain ⟨w1, w2, w3, w4⟩ := h.written 1 (le_refl _) hk j hj hjn
    rw [w4, w3 rfl]
    have := hM 0 (by omega) j hjn 0 (by omega)
    rw [extend_lin T hdur] at this
    have hz : s.potential (1 - 1) 0 = 0 := h.zero
    rw [hz]
    simpa using this
  | k2 + 1, hk, j, hj, hjn => by
    obtain ⟨w1, w2, w3, w4⟩ := h.written (k2 + 1 + 1) (by omega) hk j hj hjn
    rw [w4]
    have a1 := LFDqInv.bounded_rows h hdur M hM0 hM k2 (by omega) (s.pred (k2 + 1 + 1) j)
      (by omega) (by omega)
    have a2 := hM (k2 + 1) (by omega) j hjn _ w2
    rw [extend_lin T hdur] at a2
    have e : k2 + 1 + 1 - 1 = k2 + 1 := rfl
    rw [e]
    refine le_trans (propagateFrom_mono p T a1 _ _) ?_
    push_cast at a2 ⊢
    exact a2

theorem WholeLoads.sum_le {p : Params} {T : List Int} (h : WholeLoads p T) :
    (T.map p.demand).sum ≤ 2 ^ 53 := by
  have := h.sum
  have e : (2 : ℚ) ^ 51 ≤ 2 ^ 53 := by norm_num
  linarith

/-- The test of the inner loop of the Bellman algorithm, for whole loads. -/
theorem WholeLoads.guard_iff {p : Params} {T : List Int} (h : WholeLoads p T) {i t : Nat}
    (hit : i ≤ t) (ht : t ≤ p.nbClients) :
    loadB p T i t ≤ fmul (3 / 2) p.vehicleCapacity ↔
      2 * (loadTo p T t - loadTo p T i) ≤ 3 * p.vehicleCapacity := by
  obtain ⟨q, q1, q2, q3⟩ := h.cap
  have e := loadB_exact p T h.dem h.sum_le i (t - i) (by rw [h.len]; omega)
  rw [Nat.add_sub_cancel' hit] at e
  rw [e, q2, fmul_half q q3]
  constructor <;> intro g <;> linarith

theorem WholeLoads.load_mono {p : Params} {T : List Int} (h : WholeLoads p T) {a b : Nat}
    (hab : a ≤ b) (hb : b ≤ p.nbClients) : loadTo p T a ≤ loadTo p T b :=
  loadTo_mono_take p T h.dem h.sum_le hab (by rw [h.len]; exact hb)

theorem WholeLoads.cap_pos {p : Params} {T : List Int} (h : WholeLoads p T) :
    0 < p.vehicleCapacity := by
  obtain ⟨q, q1, q2, q3⟩ := h.cap
  rw [q2]
  exact_mod_cast q1

theorem guard_extend {p : Params} {T : List Int} (h : WholeLoads p T) (i : Nat) :
    ∀ (d j : Nat), j + d = p.nbClients → i < j → Guarded p T i j →
    ∃ G, j ≤ G ∧ G ≤ p.nbClients ∧ Guarded p T i G ∧
      (G = p.nbClients ∨ 3 * p.vehicleCapacity < 2 * (loadTo p T G - loadTo p T i))
  | 0, j, hd, _, hg => ⟨j, le_refl _, by omega, hg, Or.inl (by omega)⟩
  | d + 1, j, hd, hj, hg => by
    by_cases c : 2 * (loadTo p T j - loadTo p T i) ≤ 3 * p.vehicleCapacity
    · have hg2 : Guarded p T i (j + 1) := by
        intro t h1 h2
        by_cases e : t = j
        · subst e
          exact (h.guard_iff h2 (by omega)).2 c
        · exact hg t (by omega) h2
      obtain ⟨G, g1, g2, g3, g4⟩ := guard_extend h i d (j + 1) (by omega) (by omega) hg2
      exact ⟨G, by omega, g2, g3, g4⟩
    · exact ⟨j, le_refl _, by omega, hg, Or.inr (lt_of_not_le c)⟩

theorem Guarded.shorter {p : Params} {T : List Int} {i j : Nat} (h : Guarded p T i j) {j2 : Nat}
    (hj : j2 ≤ j) : Guarded p T i j2 :=
  fun t h1 h2 => h t (by omega) h2

theorem Guarded.single {p : Params} {T : List Int} (hQ : 0 ≤ p.vehicleCapacity) (i : Nat) :
    Guarded p T i (i + 1) := by
  intro t h1 h2
  have : t = i := by omega
  subst this
  rw [loadB_self]
  exact fmul_nonneg (by norm_num) hQ

end Split
namespace Split

/-- The Bellman algorithm of `splitLF` reaches, with `k` routes, every position from `k` up
to a position `G` that is the last one or carries a load of at least `1.5 * k` times the
capacity: the potentials of these positions are at most `k` times the bound of the route
costs. -/
theorem lf_reach {p : Params} {T : List Int} (hdur : p.isDurationConstraint = true) {K : Nat}
    {s : Split} (h : LFDurInv p T K s 0) (hw : WholeLoads p T) (M : ℚ) (hM0 : 0 ≤ M)
    (hM : ∀ k : Nat, k < p.nbClients → ∀ b, b ≤ p.nbClients → ∀ a, a < b →
      extend p T ((k : ℚ) * M) a b ≤ ((k : ℚ) + 1) * M)
    (hnM : (p.nbClients : ℚ) * M < LIM) :
    ∀ k : Nat, k ≤ K → k ≤ p.nbClients → ∃ G, k ≤ G ∧ G ≤ p.nbClients ∧
      (∀ j, k ≤ j → j ≤ G →
        ((List.range k).foldl
          (fun (s : Split) (k : Nat) => lf_bellman_level p k (p.nbClients - k) k s)
          s).potential k j ≤ (k : ℚ) * M) ∧
      (G = p.nbClients ∨ 3 * (k : ℚ) * p.vehicleCapacity ≤ 2 * loadTo p T G)
  | 0, _, _ => by
    refine ⟨0, le_refl _, Nat.zero_le _, fun j h1 h2 => ?_, Or.inr ?_⟩
    · have : j = 0 := by omega
      subst this
      simp only [List.range_zero, List.foldl_nil, Nat.cast_zero, zero_mul]
      exact le_of_eq h.zero
    · simp [loadTo]
  | k + 1, hk, hkn => by
    have hQ := le_of_lt hw.cap_pos
    obtain ⟨G, g1, g2, g3, g4⟩ := lf_reach hdur h hw M hM0 hM hnM k (by omega) (by omega)
    obtain ⟨a1, a2⟩ := h.lfdur_fold hdur k (by omega)
    obtain ⟨b1, b2, e, e1, e2, e3⟩ := a1.lfdur_level hdur (show k < K by omega)
    obtain ⟨e4, e5⟩ := e3 (by omega)
    rw [List.range_succ, List.foldl_append]
    simp only [List.foldl_cons, List.foldl_nil]
    generalize (List.range k).foldl
      (fun (s : Split) (k : Nat) => lf_bellman_level p k (p.nbClients - k) k s) s = sk
      at g3 a1 a2 b1 b2 e2 e5 ⊢
    generalize hs2 : lf_bellman_level p k (p.nbClients - k) k sk = s2 at b1 b2 e2 e5 ⊢
    have hrow : ∀ j, s2.potential k j = sk.potential k j :=
      fun j => (e2.rows k j (Or.inl (by omega))).1
    have hkM : ∀ j, k ≤ j → j ≤ G → sk.potential k j < LIM := by
      intro j j1 j2
      have c1 := g3 j j1 j2
      have c2 : (k : ℚ) ≤ (p.nbClients : ℚ) := by exact_mod_cast (by omega : k ≤ p.nbClients)
      have c3 := mul_le_mul_of_nonneg_right c2 hM0
      linarith
    have hproc : ∀ i2, k ≤ i2 → i2 ≤ G → i2 < p.nbClients → i2 < e := by
      intro i2 i1 i3 i4
      by_contra hc
      have c1 := e5 (by omega)
      rw [hrow] at c1
      exact c1 (hkM e e1 (by omega))
    have hrel : ∀ j, j ≤ p.nbClients → ∀ i2, k ≤ i2 → i2 ≤ G → i2 < j → Guarded p T i2 j →
        s2.potential (k + 1) j ≤ ((k + 1 : Nat) : ℚ) * M := by
      intro j hj i2 h1 h2 h3 h4
      have c1 := e2.relaxed j hj i2 h1 (hproc i2 h1 h2 (by omega)) h3 h4
      rw [hrow] at c1
      have c2 := g3 i2 h1 h2
      have c3 := hM k (by omega) j hj i2 h3
      rw [extend_dur T hdur] at c3
      push_cast
      exact le_trans c1 (le_trans (fadd_mono_left _ c2) c3)
    have hone : ∀ j, k + 1 ≤ j → j ≤ p.nbClients → j ≤ G + 1 →
        s2.potential (k + 1) j ≤ ((k + 1 : Nat) : ℚ) * M := by
      intro j j1 j2 j3
      refine hrel j j2 (j - 1) (by omega) (by omega) (by omega) ?_
      have c := Guarded.single (T := T) hQ (j - 1)
      rwa [Nat.sub_add_cancel (by omega)] at c
    by_cases hG : G = p.nbClients
    · exact ⟨p.nbClients, hkn, le_refl _, fun j j1 j2 => hone j j1 j2 (by omega), Or.inl rfl⟩
    · obtain ⟨G2, q1, q2, q3, q4⟩ := guard_extend hw G (p.nbClients - G - 1)
        (G + 1) (by omega) (by omega) (Guarded.single hQ G)
      refine ⟨G2, by omega, q2, fun j j1 j2 => ?_, ?_⟩
      · by_cases c : j ≤ G
        · exact hone j j1 (by omega) (by omega)
        · exact hrel j (by omega) G g1 (le_refl _) (by omega) (q3.shorter j2)
      · rcases q4 with q | q
        · exact Or.inl q
        · right
          rcases g4 with g | g
          · omega
          · have e : 3 * ((k + 1 : Nat) : ℚ) * p.vehicleCapacity =
                3 * (k : ℚ) * p.vehicleCapacity + 3 * p.vehicleCapacity := by
              push_cast
              ring
            rw [e]
            linarith

end Split
namespace Split

/-- After the main algorithm of `splitSimple`, in both branches, the potential of every
position is at most the position times the bound of the route costs, and the predecessor
of a position of the tour is before it. -/
theorem simple_potentials_small {p : Params} {T : List Int} {sp : Split} (hP : Prepared p T sp)
    (M : ℚ) (hM0 : 0 ≤ M)
    (hM : ∀ k : Nat, k < p.nbClients → ∀ b, b ≤ p.nbClients → ∀ a, a < b →
      extend p T ((k : ℚ) * M) a b ≤ ((k : ℚ) + 1) * M)
    (hnM : (p.nbClients : ℚ) * M < LIM) (hQ : 0 ≤ p.vehicleCapacity) :
    ∀ j, j ≤ p.nbClients → (simple_potentials p sp).potential 0 j ≤ (j : ℚ) * M ∧
      (1 ≤ j → (simple_potentials p sp).pred 0 j < j) := by
  intro j hj
  have hlim := LIM_lt_INF
  by_cases hdur : p.isDurationConstraint = true
  · have h := bellman_final hdur hP
    have c1 := h.optimal (Path.singles hQ j hj)
    have c2 := singlesTo_le hdur M hM j hj
    refine ⟨le_trans c1 c2, fun j1 => ?_⟩
    have c3 : (j : ℚ) ≤ (p.nbClients : ℚ) := by exact_mod_cast hj
    have c4 := mul_le_mul_of_nonneg_right c3 hM0
    exact (h.last j j1 hj (by linarith)).1
  · have hdur2 : p.isDurationConstraint = false := by simpa using hdur
    have h := deque_final hdur2 hP
    exact ⟨h.bounded hdur2 M hM0 hM j (by omega) hj, fun j1 => (h.written j j1 (by omega)).1⟩

/-- Method `splitSimple` does not throw when the route costs are small against the limit
`1.e29`, and it returns `false` only if the tour has more positions than the number of
vehicles. -/
theorem splitSimple_total {p : Params} {T : List Int} {sp : Split} (hP : Prepared p T sp)
    (hb : ∀ a b, sp.pred a b ≤ b) (M : ℚ) (hM0 : 0 ≤ M)
    (hM : ∀ k : Nat, k < p.nbClients → ∀ b, b ≤ p.nbClients → ∀ a, a < b →
      extend p T ((k : ℚ) * M) a b ≤ ((k : ℚ) + 1) * M)
    (hnM : (p.nbClients : ℚ) * M < LIM) (hQ : 0 ≤ p.vehicleCapacity)
    (R : Nat → List Int) :
    ∃ r, splitSimple p sp ⟨T, R⟩ = some r ∧ r.2.1 = simple_potentials p sp ∧ r.2.2.chromT = T ∧
      (r.1 = false → sp.maxVehicles.toNat < p.nbClients) := by
  obtain ⟨a1, a2, a3⟩ := simple_potentials_spec hP hb
  have hs := simple_potentials_small hP M hM0 hM hnM hQ
  unfold splitSimple
  simp only
  have c : ¬ (simple_potentials p sp).potential 0 p.nbClients > LIM := by
    have := (hs p.nbClients (le_refl _)).1
    linarith
  rw [if_neg c]
  refine ⟨_, rfl, rfl, rfl, fun h => ?_⟩
  simp only [decide_eq_false_iff_not] at h
  rw [fill_end, a2] at h
  have := chain_le (simple_potentials p sp).pred (fun _ => 0) p.nbClients
    (fun _ j j1 j2 => (hs j j2).2 j1) a3 sp.maxVehicles.toNat p.nbClients (le_refl _)
  omega

/-- Method `splitLF` does not throw when the route costs are small against the limit
`1.e29`, the loads are whole, and the number of vehicles is at least one, at most the
number of positions, and enough to carry the total load. -/
theorem splitLF_total {p : Params} {T : List Int} {sp : Split} (hP : Prepared p T sp)
    (hb : ∀ a b, sp.pred a b ≤ b)
    (h0 : p.isDurationConstraint = false → SmallL0 p T) (hw : WholeLoads p T) (M : ℚ)
    (hM0 : 0 ≤ M)
    (hM : ∀ k : Nat, k < p.nbClients → ∀ b, b ≤ p.nbClients → ∀ a, a < b →
      extend p T ((k : ℚ) * M) a b ≤ ((k : ℚ) + 1) * M)
    (hnM : (p.nbClients : ℚ) * M < LIM)
    (hK1 : 1 ≤ sp.maxVehicles.toNat) (hKn : sp.maxVehicles.toNat ≤ p.nbClients)
    (hKQ : loadTo p T p.nbClients ≤ (sp.maxVehicles.toNat : ℚ) * p.vehicleCapacity)
    (R : Nat → List Int) :
    ∃ r, splitLF p sp ⟨T, R⟩ = some r := by
  have hQ := hw.cap_pos
  generalize hK : sp.maxVehicles.toNat = K at hK1 hKn hKQ
  have c3 : (K : ℚ) ≤ (p.nbClients : ℚ) := by exact_mod_cast hKn
  have c4 := mul_le_mul_of_nonneg_right c3 hM0
  have c : ¬ (lf_potentials p K sp).potential K p.nbClients > LIM := by
    unfold lf_potentials
    simp only
    by_cases hdur : p.isDurationConstraint = true
    · rw [if_pos hdur]
      obtain ⟨G, g1, g2, g3, g4⟩ := lf_reach hdur (LFDurInv.lfdur_init hP hb K) hw M hM0 hM hnM
        K (le_refl _) hKn
      rcases g4 with g | g
      · subst g
        have := g3 p.nbClients hKn (le_refl _)
        linarith
      · exfalso
        have m := hw.load_mono g2 (le_refl _)
        have k1 : (1 : ℚ) ≤ (K : ℚ) := by exact_mod_cast hK1
        have k2 := mul_le_mul_of_nonneg_right k1 (le_of_lt hQ)
        rw [one_mul] at k2
        linarith
    · have hdur2 : p.isDurationConstraint = false := by simpa using hdur
      rw [if_neg hdur]
      obtain ⟨a1, a2⟩ := (LFDqInv.lfdq_init hP hb K).lfdq_fold hdur2 (h0 hdur2) K (le_refl _)
      have := a1.bounded_rows hdur2 M hM0 hM (K - 1) (by omega) p.nbClients (by omega) (le_refl _)
      rw [Nat.sub_add_cancel hK1] at this
      linarith
  unfold splitLF
  simp only
  rw [hK, if_neg c]
  exact ⟨_, rfl⟩

end Split
namespace Split

/-- Method `generalSplit` does not throw when the route costs are small against the limit
`1.e29`, the loads are whole and sum to `totalDemand`, the conversion of the quotient
`totalDemand / vehicleCapacity` to `int` is defined, and at least one vehicle is used. -/
theorem generalSplit_total {p : Params} {T : List Int} {sp : Split} (hbase : Base sp)
    (h0 : p.isDurationConstraint = false → SmallL0 p T) (hw : WholeLoads p T)
    (nbMaxVehicles : Int) (M : ℚ) (hM0 : 0 ≤ M)
    (hM : ∀ k : Nat, k < p.nbClients → ∀ b, b ≤ p.nbClients → ∀ a, a < b →
      extend p T ((k : ℚ) * M) a b ≤ ((k : ℚ) + 1) * M)
    (hnM : (p.nbClients : ℚ) * M < LIM)
    (htot : p.totalDemand = (T.map p.demand).sum) {lower : Int}
    (hlow : ceil_div p.totalDemand p.vehicleCapacity = some lower)
    (hK1 : 1 ≤ max nbMaxVehicles lower)
    (R : Nat → List Int) :
    ∃ r, generalSplit p sp ⟨T, R⟩ nbMaxVehicles = some r := by
  have hQ := hw.cap_pos
  unfold generalSplit
  rw [hlow]
  simp only
  generalize hsp1 : ({ sp with maxVehicles := max nbMaxVehicles lower } : Split) = sp1
  have hb1 : Base sp1 := by
    rw [← hsp1]
    exact ⟨hbase.dnext0, hbase.load0, hbase.serv0, hbase.dist0, hbase.pred_le⟩
  have hm1 : sp1.maxVehicles = max nbMaxVehicles lower := by
    rw [← hsp1]
  obtain ⟨q1, q2, q3, q4, q5⟩ := prepare_spec p T sp1 hb1
  obtain ⟨r1, h1, s1, s2, s3⟩ :=
    splitSimple_total q1 q2.pred_le M hM0 hM hnM (le_of_lt hQ) R
  rw [h1]
  obtain ⟨ok, sp3, indiv3⟩ := r1
  simp only at s1 s2 s3 ⊢
  by_cases hok : ok = true
  · rw [if_pos hok]
    exact ⟨_, rfl⟩
  · rw [if_neg hok]
    have hok2 : ok = false := by simpa using hok
    obtain ⟨t1, t2, t3⟩ := simple_potentials_spec q1 q2.pred_le
    rw [← s1] at t1 t2 t3
    have hmv : sp3.maxVehicles = max nbMaxVehicles lower := by
      rw [t2, q5, hm1]
    have hKn := s3 hok2
    rw [q5, hm1, ← hmv] at hKn
    obtain ⟨T3, R3⟩ := indiv3
    simp only at s2
    subst s2
    have hcast : ((sp3.maxVehicles.toNat : Nat) : Int) = sp3.maxVehicles :=
      Int.toNat_of_nonneg (by omega)
    have hKQ : loadTo p T3 p.nbClients ≤ (sp3.maxVehicles.toNat : ℚ) * p.vehicleCapacity := by
      have e1 : ((sp3.maxVehicles.toNat : Nat) : ℚ) = ((sp3.maxVehicles : Int) : ℚ) := by
        rw [← hcast]
        push_cast
        rfl
      rw [e1]
      have hl := ceil_div_some hQ hlow
      obtain ⟨q, qa, qb, qc⟩ := hw.cap
      obtain ⟨z, hz, hz0⟩ := whole_sum p.demand hw.dem T3
      have e2 : loadTo p T3 p.nbClients = (T3.map p.demand).sum := by
        have := loadTo_take p T3 hw.dem hw.sum_le p.nbClients (by rw [hw.len])
        rw [this, ← hw.len, List.take_length]
      have e3 : (T3.map p.demand).sum = ((z.toNat : Nat) : ℚ) := by
        rw [hz]
        have : ((z.toNat : Nat) : Int) = z := Int.toNat_of_nonneg hz0
        exact_mod_cast this.symm
      have htd : z.toNat < 2 ^ 51 := by
        have := hw.sum
        rw [e3] at this
        exact_mod_cast this
      have c1 := ceil_quotient z.toNat q qa htd (by exact_mod_cast qc)
      rw [← e3, ← qb, ← htot, ← hl] at c1
      have c2 : lower ≤ sp3.maxVehicles := by
        rw [hmv]; exact le_max_right _ _
      have c2q : (lower : ℚ) ≤ ((sp3.maxVehicles : Int) : ℚ) := by exact_mod_cast c2
      have c3 := mul_le_mul_of_nonneg_right c2q (le_of_lt hQ)
      rw [e2, ← htot]
      linarith
    obtain ⟨r2, h2⟩ := splitLF_total t1 t3 h0 hw M hM0 hM hnM (by omega)
      (le_of_lt hKn) hKQ R3
    rw [h2]
    obtain ⟨ok2, sp4, indiv4⟩ := r2
    exact ⟨_, rfl⟩

end Split
theorem Whole.natCast (n : Nat) : Whole (n : ℚ) := ⟨(n : Int), by push_cast; rfl⟩

theorem Whole.zero : Whole 0 := ⟨0, by simp⟩

theorem Whole.add {a b : ℚ} (ha : Whole a) (hb : Whole b) : Whole (a + b) := by
  obtain ⟨x, rfl⟩ := ha
  obtain ⟨y, rfl⟩ := hb
  exact ⟨x + y, by push_cast; rfl⟩

theorem Whole.sub {a b : ℚ} (ha : Whole a) (hb : Whole b) : Whole (a - b) := by
  obtain ⟨x, rfl⟩ := ha
  obtain ⟨y, rfl⟩ := hb
  exact ⟨x - y, by push_cast; rfl⟩

theorem Whole.mul {a b : ℚ} (ha : Whole a) (hb : Whole b) : Whole (a * b) := by
  obtain ⟨x, rfl⟩ := ha
  obtain ⟨y, rfl⟩ := hb
  exact ⟨x * y, by push_cast; rfl⟩

theorem Whole.max {a b : ℚ} (ha : Whole a) (hb : Whole b) : Whole (max a b) := by
  rcases le_total a b with h | h
  · rw [max_eq_right h]; exact hb
  · rw [max_eq_left h]; exact ha

/-- Two whole numbers that differ by less than one are in order. -/
theorem Whole.le_of_lt_add {a b E : ℚ} (ha : Whole a) (hb : Whole b) (hE : E ≤ 1)
    (h : a < b + E) : a ≤ b := by
  obtain ⟨x, rfl⟩ := ha
  obtain ⟨y, rfl⟩ := hb
  have h1 : (x : ℚ) < ((y + 1 : Int) : ℚ) := by push_cast; linarith
  have h2 : x < y + 1 := by exact_mod_cast h1
  have h3 : x ≤ y := by omega
  exact_mod_cast h3

theorem fadd_whole {a b : ℚ} (ha : Whole a) (hb : Whole b) (h : |a + b| ≤ 2 ^ 53) :
    fadd a b = a + b :=
  binary64_whole (ha.add hb) h

theorem fsub_whole {a b : ℚ} (ha : Whole a) (hb : Whole b) (h : |a - b| ≤ 2 ^ 53) :
    fsub a b = a - b :=
  binary64_whole (ha.sub hb) h

theorem fmul_whole {a b : ℚ} (ha : Whole a) (hb : Whole b) (h : |a * b| ≤ 2 ^ 53) :
    fmul a b = a * b :=
  binary64_whole (ha.mul hb) h

/-- A tolerance between `2 ^ (-17)` and 1 added to a whole number below `2 ^ 35` gives a
value of type `double` above the number and at most one above it. -/
theorem tolerance_add {R E : ℚ} (hR : Whole R) (hR1 : |R| < 2 ^ 35) (hE1 : pow2 (-17) ≤ E)
    (hE2 : E ≤ 1) : R < fadd R E ∧ fadd R E ≤ R + 1 := by
  obtain ⟨z, rfl⟩ := hR
  have hz : |z| < 2 ^ 35 := by
    have : |((z : Int) : ℚ)| = ((|z| : Int) : ℚ) := by simp
    rw [this] at hR1
    exact_mod_cast hR1
  have hz2 := abs_lt.1 hz
  unfold fadd
  constructor
  · have hd := binary64_dyadic (z * 2 ^ 17 + 1) (-17) (by
      rw [abs_lt]
      constructor <;> omega) (by norm_num)
    have e : ((z * 2 ^ 17 + 1 : Int) : ℚ) * pow2 (-17) = (z : ℚ) + pow2 (-17) := by
      rw [pow2_eq]
      push_cast
      norm_num
      ring
    rw [e] at hd
    have := binary64_ge_of_ge hd (show (z : ℚ) + pow2 (-17) ≤ (z : ℚ) + E by linarith)
    have hp := pow2_pos (-17)
    linarith
  · have hd := binary64_int (z + 1) (by
      rw [abs_le]
      constructor <;> omega)
    push_cast at hd
    exact binary64_le_of_le hd (by linarith)

/-- A tolerance between `2 ^ (-17)` and 1 taken from a whole number below `2 ^ 35` gives a
value of type `double` below the number and at most one below it. -/
theorem tolerance_sub {R E : ℚ} (hR : Whole R) (hR1 : |R| < 2 ^ 35) (hE1 : pow2 (-17) ≤ E)
    (hE2 : E ≤ 1) : R - 1 ≤ fsub R E ∧ fsub R E < R := by
  obtain ⟨z, rfl⟩ := hR
  have hz : |z| < 2 ^ 35 := by
    have : |((z : Int) : ℚ)| = ((|z| : Int) : ℚ) := by simp
    rw [this] at hR1
    exact_mod_cast hR1
  have hz2 := abs_lt.1 hz
  unfold fsub
  constructor
  · have hd := binary64_int (z - 1) (by
      rw [abs_le]
      constructor <;> omega)
    push_cast at hd
    exact binary64_ge_of_ge hd (by linarith)
  · have hd := binary64_dyadic (z * 2 ^ 17 - 1) (-17) (by
      rw [abs_lt]
      constructor <;> omega) (by norm_num)
    have e : ((z * 2 ^ 17 - 1 : Int) : ℚ) * pow2 (-17) = (z : ℚ) - pow2 (-17) := by
      rw [pow2_eq]
      push_cast
      norm_num
      ring
    rw [e] at hd
    have := binary64_le_of_le hd (show (z : ℚ) - E ≤ (z : ℚ) - pow2 (-17) by linarith)
    have hp := pow2_pos (-17)
    linarith
namespace Split

theorem WholeCosts.W_nonneg {p : Params} {T : List Int} {W : Nat} (hw : WholeCosts p T W) :
    (0 : ℚ) ≤ (W : ℚ) := Nat.cast_nonneg W

theorem WholeCosts.small_q {p : Params} {T : List Int} {W : Nat} (hw : WholeCosts p T W) :
    ((p.nbClients : ℚ) + 3) * hopBound p W < 2 ^ 35 := by
  have h := hw.small
  have h2 : (((p.nbClients + 3) * (p.nbClients + 3) * W : Nat) : ℚ) < ((2 ^ 35 : Nat) : ℚ) := by
    exact_mod_cast h
  unfold hopBound
  push_cast at h2
  linarith

theorem hopBound_nonneg (p : Params) (W : Nat) : 0 ≤ hopBound p W := by
  unfold hopBound
  positivity

theorem WholeCosts.W_le {p : Params} {T : List Int} {W : Nat} (hw : WholeCosts p T W) :
    (W : ℚ) ≤ hopBound p W := by
  unfold hopBound
  have h1 : (0 : ℚ) ≤ (p.nbClients : ℚ) := Nat.cast_nonneg _
  have h2 := hw.W_nonneg
  nlinarith

/-- A multiple `k * (n + 3) * W` with `k <= n + 3` is below `2 ^ 35`. -/
theorem WholeCosts.mult_lt {p : Params} {T : List Int} {W : Nat} (hw : WholeCosts p T W)
    {k : ℚ} (hk : k ≤ (p.nbClients : ℚ) + 3) : k * hopBound p W < 2 ^ 35 :=
  lt_of_le_of_lt (mul_le_mul_of_nonneg_right hk (hopBound_nonneg p W)) hw.small_q

theorem WholeCosts.exact {p : Params} {T : List Int} {W : Nat} (hw : WholeCosts p T W)
    {x : ℚ} (h0 : 0 ≤ x) (h1 : x ≤ ((p.nbClients : ℚ) + 3) * hopBound p W) : |x| ≤ 2 ^ 53 := by
  rw [abs_of_nonneg h0]
  have := hw.small_q
  have e : (2 : ℚ) ^ 35 ≤ 2 ^ 53 := by norm_num
  linarith

theorem WholeCosts.dist_whole {p : Params} {T : List Int} {W : Nat} (hw : WholeCosts p T W)
    (a b : Int) : Whole (p.timeCost a b) ∧ 0 ≤ p.timeCost a b ∧ p.timeCost a b ≤ (W : ℚ) := by
  obtain ⟨d, hd, hdW⟩ := hw.dist a b
  rw [hd]
  exact ⟨Whole.natCast d, Nat.cast_nonneg d, by exact_mod_cast hdW⟩

theorem WholeCosts.dem_nonneg {p : Params} {T : List Int} {W : Nat} (hw : WholeCosts p T W)
    (c : Int) : 0 ≤ p.demand c := by
  obtain ⟨d, hd⟩ := hw.dem c
  rw [hd]
  exact Nat.cast_nonneg d

theorem WholeCosts.pen_nonneg {p : Params} {T : List Int} {W : Nat} (hw : WholeCosts p T W) :
    0 ≤ p.penaltyCapacity := by
  obtain ⟨a, ha⟩ := hw.pcoef
  rw [ha]
  exact Nat.cast_nonneg a

theorem WholeCosts.sum_le53 {p : Params} {T : List Int} {W : Nat} (hw : WholeCosts p T W) :
    (T.map p.demand).sum ≤ 2 ^ 53 := by
  have h1 := hw.load
  have h2 := hw.W_le
  have h3 := hw.mult_lt (show (1 : ℚ) ≤ (p.nbClients : ℚ) + 3 by
    have : (0 : ℚ) ≤ (p.nbClients : ℚ) := Nat.cast_nonneg _
    linarith)
  have e : (2 : ℚ) ^ 35 ≤ 2 ^ 53 := by norm_num
  linarith

/-- The sums of demands are whole, not negative, and at most `W`. -/
theorem WholeCosts.load_whole {p : Params} {T : List Int} {W : Nat} (hw : WholeCosts p T W)
    {j : Nat} (hj : j ≤ p.nbClients) :
    Whole (loadTo p T j) ∧ 0 ≤ loadTo p T j ∧ loadTo p T j ≤ (W : ℚ) := by
  rw [loadTo_take p T hw.dem hw.sum_le53 j (by rw [hw.len]; exact hj)]
  obtain ⟨z, hz, hz0⟩ := whole_sum p.demand hw.dem (T.take j)
  have := sum_take_le p.demand hw.dem_nonneg T j
  refine ⟨⟨z, hz⟩, by rw [hz]; exact_mod_cast hz0, le_trans this hw.load⟩

theorem WholeCosts.loads_mono {p : Params} {T : List Int} {W : Nat} (hw : WholeCosts p T W)
    {a b : Nat} (hab : a ≤ b) (hb : b ≤ p.nbClients) : loadTo p T a ≤ loadTo p T b :=
  loadTo_mono_take p T hw.dem hw.sum_le53 hab (by rw [hw.len]; exact hb)

/-- One step of the sums of distances is exact. -/
theorem WholeCosts.dist_step {p : Params} {T : List Int} {W : Nat} (hw : WholeCosts p T W)
    {j : Nat} (hj : j + 1 ≤ p.nbClients) (i1 : Whole (distTo p T j)) (i2 : 0 ≤ distTo p T j)
    (i3 : distTo p T j ≤ (j : ℚ) * (W : ℚ)) :
    distTo p T (j + 1) =
      distTo p T j + (if j = 0 then 0 else p.timeCost (cust T j) (cust T (j + 1))) ∧
    Whole (if j = 0 then 0 else p.timeCost (cust T j) (cust T (j + 1))) ∧
    (0 : ℚ) ≤ (if j = 0 then 0 else p.timeCost (cust T j) (cust T (j + 1))) ∧
    (if j = 0 then 0 else p.timeCost (cust T j) (cust T (j + 1))) ≤ (W : ℚ) := by
  obtain ⟨d1, d2, d3⟩ := hw.dist_whole (cust T j) (cust T (j + 1))
  have hwn := hw.W_nonneg
  have e : distTo p T (j + 1) =
      fadd (distTo p T j) (if j = 0 then 0 else p.timeCost (cust T j) (cust T (j + 1))) := by
    show fadd (distTo p T j) (if j = 0 then 0 else (client p T j).dnext) = _
    by_cases j0 : j = 0
    · rw [if_pos j0, if_pos j0]
    · rw [if_neg j0, if_neg j0]
      simp only [client]
      rw [if_pos (by omega)]
  have hw2 : Whole (if j = 0 then 0 else p.timeCost (cust T j) (cust T (j + 1))) := by
    split_ifs
    · exact Whole.zero
    · exact d1
  have h0 : (0 : ℚ) ≤ (if j = 0 then 0 else p.timeCost (cust T j) (cust T (j + 1))) := by
    split_ifs
    · exact le_refl _
    · exact d2
  have hW : (if j = 0 then 0 else p.timeCost (cust T j) (cust T (j + 1))) ≤ (W : ℚ) := by
    split_ifs
    · exact hwn
    · exact d3
  refine ⟨?_, hw2, h0, hW⟩
  rw [e]
  refine fadd_whole i1 hw2 (hw.exact (by linarith) ?_)
  have hjn : (j : ℚ) + 1 ≤ (p.nbClients : ℚ) + 3 := by
    have : ((j + 1 : Nat) : ℚ) ≤ (p.nbClients : ℚ) := by exact_mod_cast hj
    push_cast at this
    linarith
  have h5 := mul_le_mul_of_nonneg_right hjn hwn
  have h6 := mul_le_mul_of_nonneg_left hw.W_le
    (show (0 : ℚ) ≤ (p.nbClients : ℚ) + 3 by
      have : (0 : ℚ) ≤ (p.nbClients : ℚ) := Nat.cast_nonneg _
      linarith)
  linarith

/-- The sums of distances are whole, not negative, and at most `n * W`. -/
theorem WholeCosts.dist_sum {p : Params} {T : List Int} {W : Nat} (hw : WholeCosts p T W) :
    ∀ j : Nat, j ≤ p.nbClients →
    Whole (distTo p T j) ∧ 0 ≤ distTo p T j ∧ distTo p T j ≤ (j : ℚ) * (W : ℚ)
  | 0, _ => ⟨Whole.zero, le_refl _, by simp [distTo]⟩
  | j + 1, hj => by
    obtain ⟨i1, i2, i3⟩ := WholeCosts.dist_sum hw j (by omega)
    obtain ⟨s1, s2, s3, s4⟩ := hw.dist_step hj i1 i2 i3
    refine ⟨by rw [s1]; exact i1.add s2, by rw [s1]; linarith, ?_⟩
    rw [s1]
    push_cast
    linarith

theorem WholeCosts.dist_mono {p : Params} {T : List Int} {W : Nat} (hw : WholeCosts p T W)
    (a : Nat) : ∀ (d : Nat), a + d ≤ p.nbClients → distTo p T a ≤ distTo p T (a + d)
  | 0, _ => le_refl _
  | d + 1, h => by
    have ih := WholeCosts.dist_mono hw a d (by omega)
    obtain ⟨i1, i2, i3⟩ := hw.dist_sum (a + d) (by omega)
    obtain ⟨s1, s2, s3, s4⟩ := hw.dist_step (show a + d + 1 ≤ p.nbClients by omega) i1 i2 i3
    have e : a + (d + 1) = a + d + 1 := by omega
    rw [e, s1]
    linarith

/-- The sums of distances are at most `n * W`, which is at most the bound of a route
cost. -/
theorem WholeCosts.dist_le {p : Params} {T : List Int} {W : Nat} (hw : WholeCosts p T W)
    {j : Nat} (hj : j ≤ p.nbClients) : distTo p T j ≤ (p.nbClients : ℚ) * (W : ℚ) := by
  obtain ⟨_, _, i3⟩ := hw.dist_sum j hj
  have h1 : (j : ℚ) ≤ (p.nbClients : ℚ) := by exact_mod_cast hj
  have := mul_le_mul_of_nonneg_right h1 hw.W_nonneg
  linarith

end Split
namespace Split

theorem WholeCosts.W_lt {p : Params} {T : List Int} {W : Nat} (hw : WholeCosts p T W) :
    (W : ℚ) < 2 ^ 35 := by
  have h1 := hw.W_le
  have h3 := hw.mult_lt (show (1 : ℚ) ≤ (p.nbClients : ℚ) + 3 by
    have : (0 : ℚ) ≤ (p.nbClients : ℚ) := Nat.cast_nonneg _
    linarith)
  linarith

theorem WholeCosts.cap_whole {p : Params} {T : List Int} {W : Nat} (hw : WholeCosts p T W) :
    Whole p.vehicleCapacity ∧ 0 ≤ p.vehicleCapacity ∧ p.vehicleCapacity ≤ (W : ℚ) := by
  obtain ⟨q, hq, hqW⟩ := hw.cap
  rw [hq]
  exact ⟨Whole.natCast q, Nat.cast_nonneg q, by exact_mod_cast hqW⟩

theorem WholeCosts.pen_whole_coef {p : Params} {T : List Int} {W : Nat}
    (hw : WholeCosts p T W) : Whole p.penaltyCapacity := by
  obtain ⟨a, ha⟩ := hw.pcoef
  rw [ha]
  exact Whole.natCast a

theorem WholeCosts.load_le_sum {p : Params} {T : List Int} {W : Nat} (hw : WholeCosts p T W)
    {j : Nat} (hj : j ≤ p.nbClients) : loadTo p T j ≤ (T.map p.demand).sum := by
  rw [loadTo_take p T hw.dem hw.sum_le53 j (by rw [hw.len]; exact hj)]
  exact sum_take_le p.demand hw.dem_nonneg T j

/-- A bound by `W` makes a whole number exact. -/
theorem WholeCosts.exactW {p : Params} {T : List Int} {W : Nat} (hw : WholeCosts p T W)
    {x : ℚ} (h0 : - (W : ℚ) ≤ x) (h1 : x ≤ (W : ℚ)) : |x| ≤ 2 ^ 53 := by
  have := hw.W_lt
  have e : (2 : ℚ) ^ 35 ≤ 2 ^ 53 := by norm_num
  rw [abs_le]
  constructor <;> linarith

/-- The difference of two sums of demands and the product of the penalty with it are
exact. -/
theorem WholeCosts.load_diff {p : Params} {T : List Int} {W : Nat} (hw : WholeCosts p T W)
    {t y : Nat} (hty : t ≤ y) (hy : y ≤ p.nbClients) :
    fsub (loadTo p T y) (loadTo p T t) = loadTo p T y - loadTo p T t ∧
    Whole (loadTo p T y - loadTo p T t) ∧ 0 ≤ loadTo p T y - loadTo p T t ∧
    loadTo p T y - loadTo p T t ≤ (W : ℚ) ∧
    p.penaltyCapacity * (loadTo p T y - loadTo p T t) ≤ (W : ℚ) ∧
    fmul p.penaltyCapacity (loadTo p T y - loadTo p T t) =
      p.penaltyCapacity * (loadTo p T y - loadTo p T t) := by
  obtain ⟨a1, a2, a3⟩ := hw.load_whole hy
  obtain ⟨b1, b2, b3⟩ := hw.load_whole (show t ≤ p.nbClients by omega)
  have hm := hw.loads_mono hty hy
  have hs := hw.load_le_sum hy
  have hpc := hw.pen_nonneg
  have hd0 : 0 ≤ loadTo p T y - loadTo p T t := by linarith
  have hdW : loadTo p T y - loadTo p T t ≤ (W : ℚ) := by linarith
  have hpW : p.penaltyCapacity * (loadTo p T y - loadTo p T t) ≤ (W : ℚ) :=
    le_trans (mul_le_mul_of_nonneg_left (by linarith) hpc) hw.penload
  have hwn := hw.W_nonneg
  refine ⟨fsub_whole a1 b1 (hw.exactW (by linarith) hdW), a1.sub b1, hd0, hdW, hpW, ?_⟩
  exact fmul_whole hw.pen_whole_coef (a1.sub b1)
    (hw.exactW (by have := mul_nonneg hpc hd0; linarith) hpW)

/-- The penalty of the excess load of a route is exact. -/
theorem WholeCosts.pen_exact {p : Params} {T : List Int} {W : Nat} (hw : WholeCosts p T W)
    {t y : Nat} (hty : t ≤ y) (hy : y ≤ p.nbClients) :
    fmul p.penaltyCapacity
        (max (fsub (fsub (loadTo p T y) (loadTo p T t)) p.vehicleCapacity) 0) =
      pen p (loadTo p T y - loadTo p T t) ∧
    Whole (pen p (loadTo p T y - loadTo p T t)) ∧ 0 ≤ pen p (loadTo p T y - loadTo p T t) ∧
    pen p (loadTo p T y - loadTo p T t) ≤ (W : ℚ) := by
  obtain ⟨l1, l2, l3, l4, l5, _⟩ := hw.load_diff hty hy
  obtain ⟨c1, c2, c3⟩ := hw.cap_whole
  have hpc := hw.pen_nonneg
  have hwn := hw.W_nonneg
  have e2 : fsub (loadTo p T y - loadTo p T t) p.vehicleCapacity =
      loadTo p T y - loadTo p T t - p.vehicleCapacity :=
    fsub_whole l2 c1 (hw.exactW (by linarith) (by linarith))
  have hmw : Whole (max (loadTo p T y - loadTo p T t - p.vehicleCapacity) 0) :=
    (l2.sub c1).max Whole.zero
  have hm0 : 0 ≤ max (loadTo p T y - loadTo p T t - p.vehicleCapacity) 0 := le_max_right _ _
  have hm1 : max (loadTo p T y - loadTo p T t - p.vehicleCapacity) 0 ≤
      loadTo p T y - loadTo p T t := max_le (by linarith) l3
  have hpW : p.penaltyCapacity * max (loadTo p T y - loadTo p T t - p.vehicleCapacity) 0 ≤
      (W : ℚ) := le_trans (mul_le_mul_of_nonneg_left hm1 hpc) l5
  have hp0 : 0 ≤ p.penaltyCapacity * max (loadTo p T y - loadTo p T t - p.vehicleCapacity) 0 :=
    mul_nonneg hpc hm0
  rw [l1, e2]
  unfold pen
  exact ⟨fmul_whole hw.pen_whole_coef hmw (hw.exactW (by linarith) hpW),
    hw.pen_whole_coef.mul hmw, hp0, hpW⟩

/-- The cost of a route is whole, not negative, and at most `(n + 3) * W`. -/
theorem WholeCosts.hop_whole {p : Params} {T : List Int} {W : Nat} (hw : WholeCosts p T W)
    {t y : Nat} (hty : t < y) (hy : y ≤ p.nbClients) :
    Whole (hop p T t y) ∧ 0 ≤ hop p T t y ∧ hop p T t y ≤ hopBound p W := by
  obtain ⟨p1, p2, p3, p4⟩ := hw.pen_exact (le_of_lt hty) hy
  obtain ⟨d1, d2, d3⟩ := hw.dist_sum y hy
  obtain ⟨e1, e2, e3⟩ := hw.dist_sum (t + 1) (by omega)
  have hm := hw.dist_mono (t + 1) (y - (t + 1)) (by omega)
  rw [Nat.add_sub_cancel' (by omega : t + 1 ≤ y)] at hm
  have hdl := hw.dist_le hy
  obtain ⟨a1, a2, a3⟩ := hw.dist_whole 0 (cust T (t + 1))
  obtain ⟨b1, b2, b3⟩ := hw.dist_whole (cust T y) 0
  unfold hop hopBound
  refine ⟨(((d1.sub e1).add a1).add b1).add p2, by linarith, ?_⟩
  have : ((p.nbClients : ℚ) + 3) * (W : ℚ) = (p.nbClients : ℚ) * (W : ℚ) + 3 * (W : ℚ) := by ring
  rw [this]
  linarith

/-- The value that `propagate` computes is exact. -/
theorem WholeCosts.propagate_exact {p : Params} {T : List Int} {W : Nat}
    (hw : WholeCosts p T W) {x : ℚ} (hx : Whole x) (hx0 : 0 ≤ x)
    (hxb : x ≤ (p.nbClients : ℚ) * hopBound p W) {t y : Nat} (hty : t < y)
    (hy : y ≤ p.nbClients) : propagateFrom p T x t y = x + hop p T t y := by
  obtain ⟨p1, p2, p3, p4⟩ := hw.pen_exact (le_of_lt hty) hy
  obtain ⟨d1, d2, d3⟩ := hw.dist_sum y hy
  obtain ⟨e1, e2, e3⟩ := hw.dist_sum (t + 1) (by omega)
  have hm := hw.dist_mono (t + 1) (y - (t + 1)) (by omega)
  rw [Nat.add_sub_cancel' (by omega : t + 1 ≤ y)] at hm
  have hdl := hw.dist_le hy
  obtain ⟨a1, a2, a3⟩ := hw.dist_whole 0 (cust T (t + 1))
  obtain ⟨b1, b2, b3⟩ := hw.dist_whole (cust T y) 0
  have hwn := hw.W_nonneg
  have hB : hopBound p W = (p.nbClients : ℚ) * (W : ℚ) + 3 * (W : ℚ) := by
    unfold hopBound; ring
  have hn0 : (0 : ℚ) ≤ (p.nbClients : ℚ) := Nat.cast_nonneg _
  have hU : ∀ z : ℚ, 0 ≤ z → z ≤ x + hopBound p W → |z| ≤ 2 ^ 53 := by
    intro z z0 z1
    refine hw.exact z0 ?_
    have : ((p.nbClients : ℚ) + 3) * hopBound p W =
        (p.nbClients : ℚ) * hopBound p W + 3 * hopBound p W := by ring
    have := hopBound_nonneg p W
    linarith
  have s1 : fadd x (distTo p T y) = x + distTo p T y :=
    fadd_whole hx d1 (hU _ (by linarith) (by linarith))
  have s2 : fsub (x + distTo p T y) (distTo p T (t + 1)) =
      x + distTo p T y - distTo p T (t + 1) :=
    fsub_whole (hx.add d1) e1 (hU _ (by linarith) (by linarith))
  have s3 : fadd (x + distTo p T y - distTo p T (t + 1)) (p.timeCost 0 (cust T (t + 1))) =
      x + distTo p T y - distTo p T (t + 1) + p.timeCost 0 (cust T (t + 1)) :=
    fadd_whole ((hx.add d1).sub e1) a1 (hU _ (by linarith) (by linarith))
  have s4 : fadd (x + distTo p T y - distTo p T (t + 1) + p.timeCost 0 (cust T (t + 1)))
      (p.timeCost (cust T y) 0) =
      x + distTo p T y - distTo p T (t + 1) + p.timeCost 0 (cust T (t + 1)) +
        p.timeCost (cust T y) 0 :=
    fadd_whole (((hx.add d1).sub e1).add a1) b1 (hU _ (by linarith) (by linarith))
  have s5 : fadd (x + distTo p T y - distTo p T (t + 1) + p.timeCost 0 (cust T (t + 1)) +
      p.timeCost (cust T y) 0) (pen p (loadTo p T y - loadTo p T t)) =
      x + distTo p T y - distTo p T (t + 1) + p.timeCost 0 (cust T (t + 1)) +
        p.timeCost (cust T y) 0 + pen p (loadTo p T y - loadTo p T t) :=
    fadd_whole ((((hx.add d1).sub e1).add a1).add b1) p2 (hU _ (by linarith) (by linarith))
  unfold propagateFrom
  rw [p1, s1, s2, s3, s4, s5]
  unfold hop
  ring

end Split
namespace Split

theorem pen_mono (p : Params) (ha : 0 ≤ p.penaltyCapacity) {x y : ℚ} (h : x ≤ y) :
    pen p x ≤ pen p y := by
  unfold pen
  exact mul_le_mul_of_nonneg_left (max_le_max (by linarith) (le_refl _)) ha

theorem pen_lip (p : Params) (ha : 0 ≤ p.penaltyCapacity) (x : ℚ) {d : ℚ} (hd : 0 ≤ d) :
    pen p (x + d) ≤ pen p x + p.penaltyCapacity * d := by
  unfold pen
  rw [← mul_add]
  refine mul_le_mul_of_nonneg_left (max_le ?_ ?_) ha
  · have := le_max_left (x - p.vehicleCapacity) 0
    linarith
  · have := le_max_right (x - p.vehicleCapacity) 0
    linarith

theorem pen_zero (p : Params) {x : ℚ} (h : x ≤ p.vehicleCapacity) : pen p x = 0 := by
  unfold pen
  rw [max_eq_right (by linarith), mul_zero]

theorem pen_lin (p : Params) {x : ℚ} (h : p.vehicleCapacity ≤ x) :
    pen p x = p.penaltyCapacity * (x - p.vehicleCapacity) := by
  unfold pen
  rw [max_eq_left (by linarith)]

theorem pen_convex (p : Params) (ha : 0 ≤ p.penaltyCapacity) (u : ℚ) {d e : ℚ}
    (hd : 0 ≤ d) (he : 0 ≤ e) :
    pen p (u + e) + pen p (u + d) ≤ pen p u + pen p (u + e + d) := by
  unfold pen
  rw [← mul_add, ← mul_add]
  refine mul_le_mul_of_nonneg_left ?_ ha
  have h1 := le_max_left (u - p.vehicleCapacity) 0
  have h2 := le_max_right (u - p.vehicleCapacity) 0
  have h3 := le_max_left (u + e + d - p.vehicleCapacity) 0
  have h4 := le_max_right (u + e + d - p.vehicleCapacity) 0
  rcases le_total (u + e - p.vehicleCapacity) 0 with c1 | c1
  · rw [max_eq_right c1]
    have : max (u + d - p.vehicleCapacity) 0 ≤ max (u + e + d - p.vehicleCapacity) 0 :=
      max_le_max (by linarith) (le_refl _)
    linarith
  · rw [max_eq_left c1]
    rcases le_total (u + d - p.vehicleCapacity) 0 with c2 | c2
    · rw [max_eq_right c2]
      linarith
    · rw [max_eq_left c2]
      linarith

/-- The advantage of a later predecessor `b` over an earlier one `a` does not shrink when
the position moves on. -/
theorem hinge_diff_mono (p : Params) (T : List Int) (pot : Nat → ℚ)
    (ha : 0 ≤ p.penaltyCapacity) {a b y z : Nat} (hab : loadTo p T a ≤ loadTo p T b)
    (hyz : loadTo p T y ≤ loadTo p T z) :
    hinge p T pot b z + hinge p T pot a y ≤ hinge p T pot b y + hinge p T pot a z := by
  unfold hinge
  have h := pen_convex p ha (loadTo p T y - loadTo p T b)
    (sub_nonneg.2 hab) (sub_nonneg.2 hyz)
  have e1 : loadTo p T y - loadTo p T b + (loadTo p T z - loadTo p T y) =
      loadTo p T z - loadTo p T b := by ring
  have e2 : loadTo p T y - loadTo p T b + (loadTo p T b - loadTo p T a) =
      loadTo p T y - loadTo p T a := by ring
  have e3 : loadTo p T z - loadTo p T b + (loadTo p T b - loadTo p T a) =
      loadTo p T z - loadTo p T a := by ring
  rw [e1, e2, e3] at h
  linarith

theorem hinge_le_base (p : Params) (T : List Int) (pot : Nat → ℚ)
    (ha : 0 ≤ p.penaltyCapacity) {a b : Nat} (hab : loadTo p T a ≤ loadTo p T b) (y : Nat) :
    hinge p T pot b y ≤ hinge p T pot a y + (base p T pot b - base p T pot a) := by
  unfold hinge
  have := pen_mono p ha
    (show loadTo p T y - loadTo p T b ≤ loadTo p T y - loadTo p T a by linarith)
  linarith

theorem hinge_ge_base (p : Params) (T : List Int) (pot : Nat → ℚ)
    (ha : 0 ≤ p.penaltyCapacity) {a b : Nat} (hab : loadTo p T a ≤ loadTo p T b) (y : Nat) :
    hinge p T pot a y ≤ hinge p T pot b y + (base p T pot a - base p T pot b) +
      p.penaltyCapacity * (loadTo p T b - loadTo p T a) := by
  unfold hinge
  have h := pen_lip p ha (loadTo p T y - loadTo p T b) (sub_nonneg.2 hab)
  have e2 : loadTo p T y - loadTo p T b + (loadTo p T b - loadTo p T a) =
      loadTo p T y - loadTo p T a := by ring
  rw [e2] at h
  linarith

theorem hinge_congr (p : Params) (T : List Int) {pot pot2 : Nat → ℚ} {t : Nat}
    (h : pot2 t = pot t) (y : Nat) : hinge p T pot2 t y = hinge p T pot t y := by
  unfold hinge base
  rw [h]

theorem base_congr (p : Params) (T : List Int) {pot pot2 : Nat → ℚ} {t : Nat}
    (h : pot2 t = pot t) : base p T pot2 t = base p T pot t := by
  unfold base
  rw [h]

end Split
namespace Split

/-- Along the queue the positions and the bases grow, and the base of a later element
exceeds the base of an earlier one by at most the penalty of the load between them. -/
theorem QueueOK.queue_chain {p : Params} {T : List Int} {E : ℚ} {pot : Nat → ℚ}
    {q : Trivial_Deque} {i : Nat} (h : QueueOK p T E pot q i) (hE : 0 ≤ E) :
    ∀ (d : Nat) (u : Int), q.indexFront ≤ u → u + d ≤ q.indexBack →
    q.myDeque u ≤ q.myDeque (u + d) ∧
    base p T pot (q.myDeque u) ≤ base p T pot (q.myDeque (u + d)) ∧
    base p T pot (q.myDeque (u + d)) ≤ base p T pot (q.myDeque u) +
      p.penaltyCapacity * (loadTo p T (q.myDeque (u + d)) - loadTo p T (q.myDeque u))
  | 0, u, _, _ => by
    simp only [Nat.cast_zero, add_zero, le_refl, sub_self, mul_zero, true_and]
  | d + 1, u, h1, h2 => by
    have h3 : u + ((d + 1 : Nat) : Int) = u + (d : Int) + 1 := by push_cast; ring
    rw [h3] at h2 ⊢
    obtain ⟨a1, a2, a3⟩ := QueueOK.queue_chain h hE d u h1 (by omega)
    obtain ⟨b1, b2, b3⟩ := h.incr (u + d) (by omega) (by omega)
    refine ⟨by omega, by linarith, by linarith⟩

theorem QueueOK.between {p : Params} {T : List Int} {E : ℚ} {pot : Nat → ℚ}
    {q : Trivial_Deque} {i : Nat} (h : QueueOK p T E pot q i) (hE : 0 ≤ E) {u v : Int}
    (hu : q.indexFront ≤ u) (huv : u ≤ v) (hv : v ≤ q.indexBack) :
    q.myDeque u ≤ q.myDeque v ∧
    base p T pot (q.myDeque u) ≤ base p T pot (q.myDeque v) ∧
    base p T pot (q.myDeque v) ≤ base p T pot (q.myDeque u) +
      p.penaltyCapacity * (loadTo p T (q.myDeque v) - loadTo p T (q.myDeque u)) := by
  have e : v = u + ((v - u).toNat : Int) := by
    rw [Int.toNat_of_nonneg (by omega)]
    ring
  have := h.queue_chain hE (v - u).toNat u hu (by rw [← e]; exact hv)
  rw [← e] at this
  exact this

/-- The front of the queue is the best predecessor of position `i` among the elements of
the queue. -/
theorem QueueOK.front_best {p : Params} {T : List Int} {E : ℚ} {pot : Nat → ℚ}
    {q : Trivial_Deque} {i : Nat} (h : QueueOK p T E pot q i) (hf : FrontOK p T E pot q i)
    (hE : 0 < E) (ha : 0 ≤ p.penaltyCapacity)
    (hmono : ∀ a b, a ≤ b → b ≤ p.nbClients → loadTo p T a ≤ loadTo p T b)
    (hi : i ≤ p.nbClients) :
    ∀ u, q.indexFront ≤ u → u ≤ q.indexBack →
      hinge p T pot q.get_front i ≤ hinge p T pot (q.myDeque u) i := by
  intro u hu1 hu2
  by_cases e : u = q.indexFront
  · rw [e]
    exact le_refl _
  · have hlt : q.indexFront < q.indexBack := by omega
    have hf2 := hf hlt
    obtain ⟨b1, b2, b3⟩ := h.incr q.indexFront (le_refl _) hlt
    have hfa : q.get_front = q.myDeque q.indexFront := rfl
    have hfb : q.get_next_front = q.myDeque (q.indexFront + 1) := rfl
    rw [hfa, hfb] at hf2
    rw [hfa]
    generalize q.myDeque q.indexFront = a at *
    have hbi := h.lt (q.indexFront + 1) (by omega) (by omega)
    obtain ⟨c1, c2, c3⟩ := h.between (le_of_lt hE) (show q.indexFront ≤ q.indexFront + 1 by omega)
      (show q.indexFront + 1 ≤ u by omega) hu2
    have hci := h.lt u hu1 hu2
    generalize q.myDeque (q.indexFront + 1) = b at *
    generalize q.myDeque u = c at *
    have hLab := hmono a b (le_of_lt b1) (by omega : b ≤ p.nbClients)
    have hLbc := hmono b c c1 (by omega : c ≤ p.nbClients)
    have hsmall : loadTo p T i - loadTo p T b ≤ p.vehicleCapacity := by
      by_contra hc
      have e1 := pen_lin p (show p.vehicleCapacity ≤ loadTo p T i - loadTo p T b by linarith)
      have e2 := pen_lin p (show p.vehicleCapacity ≤ loadTo p T i - loadTo p T a by linarith)
      unfold hinge at hf2
      rw [e1, e2] at hf2
      linarith
    have e1 := pen_zero p hsmall
    have e2 := pen_zero p (show loadTo p T i - loadTo p T c ≤ p.vehicleCapacity by linarith)
    unfold hinge at hf2 ⊢
    rw [e1] at hf2
    rw [e2]
    have hpa : 0 ≤ pen p (loadTo p T i - loadTo p T a) := by
      unfold pen
      exact mul_nonneg ha (le_max_right _ _)
    linarith

/-- Removing a front that is not better than its successor by the tolerance keeps the
state of the queue. -/
theorem QueueOK.pop_front_ok {p : Params} {T : List Int} {E : ℚ} {pot : Nat → ℚ}
    {q : Trivial_Deque} {i : Nat} (h : QueueOK p T E pot q i) (hE : 0 ≤ E)
    (ha : 0 ≤ p.penaltyCapacity)
    (hmono : ∀ a b, a ≤ b → b ≤ p.nbClients → loadTo p T a ≤ loadTo p T b)
    (hi : i ≤ p.nbClients) (hs : q.indexFront < q.indexBack)
    (hc : hinge p T pot q.get_next_front i < hinge p T pot q.get_front i + E) :
    QueueOK p T E pot q.pop_front i := by
  have hfa : q.get_front = q.myDeque q.indexFront := rfl
  have hfb : q.get_next_front = q.myDeque (q.indexFront + 1) := rfl
  rw [hfa, hfb] at hc
  have e1 : q.pop_front.indexFront = q.indexFront + 1 := rfl
  have e2 : q.pop_front.indexBack = q.indexBack := rfl
  have e3 : q.pop_front.myDeque = q.myDeque := rfl
  refine ⟨by rw [e1, e2]; omega, by rw [e1]; have := h.front_nonneg; omega,
    by rw [e2]; exact h.back_le, fun u h1 h2 => ?_, fun u h1 h2 => ?_, fun t ht => ?_⟩
  · rw [e3]; exact h.lt u (by rw [e1] at h1; omega) (by rw [e2] at h2; exact h2)
  · rw [e3]; exact h.incr u (by rw [e1] at h1; omega) (by rw [e2] at h2; exact h2)
  · obtain ⟨u, u1, u2, u3⟩ := h.cover t ht
    rw [e1, e2, e3]
    have hd : ((i : ℚ) - 1 + ((q.indexFront + 1 : Int) : ℚ)) * E =
        ((i : ℚ) - 1 + (q.indexFront : ℚ)) * E + E := by push_cast; ring
    by_cases e : u = q.indexFront
    · subst e
      refine ⟨q.indexFront + 1, le_refl _, by omega, fun y y1 y2 => ?_⟩
      obtain ⟨b1, b2, b3⟩ := h.incr q.indexFront (le_refl _) hs
      have hbi := h.lt (q.indexFront + 1) (by omega) (by omega)
      have hLab := hmono _ _ (le_of_lt b1) (by omega)
      have hLiy := hmono _ _ y1 y2
      have m := hinge_diff_mono p T pot ha hLab hLiy
      have := u3 y y1 y2
      rw [hd]
      linarith
    · refine ⟨u, by omega, u2, fun y y1 y2 => ?_⟩
      have := u3 y y1 y2
      rw [hd]
      linarith

theorem QueueOK.congr {p : Params} {T : List Int} {E : ℚ} {pot pot2 : Nat → ℚ}
    {q : Trivial_Deque} {i : Nat} (h : QueueOK p T E pot q i)
    (hpot : ∀ t, t < i → pot2 t = pot t) : QueueOK p T E pot2 q i := by
  refine ⟨h.nonempty, h.front_nonneg, h.back_le, h.lt, fun u h1 h2 => ?_, fun t ht => ?_⟩
  · have l1 := h.lt u h1 (by omega)
    have l2 := h.lt (u + 1) (by omega) (by omega)
    rw [base_congr p T (hpot _ l1), base_congr p T (hpot _ l2)]
    exact h.incr u h1 h2
  · obtain ⟨u, u1, u2, u3⟩ := h.cover t ht
    refine ⟨u, u1, u2, fun y y1 y2 => ?_⟩
    rw [hinge_congr p T (hpot _ (h.lt u u1 u2)), hinge_congr p T (hpot _ ht)]
    exact u3 y y1 y2

/-- The loop that removes the backs stops at an empty queue or at a back that `i` does not
dominate from the right, and every element it removed is dominated. -/
theorem pop_back_loop_stop (p : Params) (sp : Split) (k i : Nat) : ∀ (m : Nat)
    (q : Trivial_Deque), q.indexFront ≤ q.indexBack + 1 → q.size ≤ m →
    (pop_back_loop p sp k i m q).indexFront = q.indexFront ∧
    (pop_back_loop p sp k i m q).myDeque = q.myDeque ∧
    (pop_back_loop p sp k i m q).indexBack ≤ q.indexBack ∧
    q.indexFront ≤ (pop_back_loop p sp k i m q).indexBack + 1 ∧
    (∀ u, (pop_back_loop p sp k i m q).indexBack < u → u ≤ q.indexBack →
      sp.dominatesRight p (q.myDeque u) i k = true) ∧
    (q.indexFront ≤ (pop_back_loop p sp k i m q).indexBack →
      sp.dominatesRight p (q.myDeque (pop_back_loop p sp k i m q).indexBack) i k = false)
  | 0, q, h, hm => by
    have e : q.size = q.indexBack - q.indexFront + 1 := rfl
    rw [e] at hm
    have z : ((0 : Nat) : Int) = 0 := rfl
    refine ⟨rfl, rfl, le_refl _, h, fun u h1 h2 => ?_, fun g => ?_⟩
    · have : (pop_back_loop p sp k i 0 q).indexBack = q.indexBack := rfl
      omega
    · have : (pop_back_loop p sp k i 0 q).indexBack = q.indexBack := rfl
      omega
  | m + 1, q, h, hm => by
    have e : q.size = q.indexBack - q.indexFront + 1 := rfl
    unfold pop_back_loop
    by_cases c : 0 < q.size ∧ sp.dominatesRight p q.get_back i k = true
    · rw [if_pos c]
      have hs : 0 < q.indexBack - q.indexFront + 1 := c.1
      have e4 : q.pop_back.size = q.indexBack - 1 - q.indexFront + 1 := rfl
      have e5 : q.pop_back.indexBack = q.indexBack - 1 := rfl
      have e6 : q.pop_back.indexFront = q.indexFront := rfl
      have e7 : q.pop_back.myDeque = q.myDeque := rfl
      obtain ⟨a1, a2, a3, a4, a5, a6⟩ := pop_back_loop_stop p sp k i m q.pop_back
        (by rw [e5, e6]; omega) (by rw [e4]; rw [e] at hm; push_cast at hm; omega)
      rw [e5] at a3
      rw [e6] at a1 a4 a6
      rw [e7] at a2 a5 a6
      rw [e5] at a5
      refine ⟨a1, a2, by omega, a4, fun u h1 h2 => ?_, a6⟩
      by_cases eu : u = q.indexBack
      · rw [eu]; exact c.2
      · exact a5 u h1 (by omega)
    · rw [if_neg c]
      refine ⟨rfl, rfl, le_refl _, h, fun u h1 h2 => by omega, fun g => ?_⟩
      have : ¬ sp.dominatesRight p q.get_back i k = true := fun g2 => c ⟨by rw [e]; omega, g2⟩
      simpa using this

end Split
namespace Split

theorem PotOK.le_n {p : Params} {W : Nat} {pot : Nat → ℚ} {i : Nat} (h : PotOK p W pot i)
    {t : Nat} (ht : t < i) (htn : t ≤ p.nbClients) :
    pot t ≤ (p.nbClients : ℚ) * hopBound p W := by
  obtain ⟨_, _, h3⟩ := h t ht htn
  have h1 : (t : ℚ) ≤ (p.nbClients : ℚ) := by exact_mod_cast htn
  exact le_trans h3 (mul_le_mul_of_nonneg_right h1 (hopBound_nonneg p W))

/-- In the linear algorithm of `splitSimple` on whole costs, the potentials written so far
are whole and bounded, and each is the potential of its predecessor plus the exact cost of
the route between them. -/
theorem DequeInv.whole {p : Params} {T : List Int} {W : Nat} {s0 s : Split} {i : Nat}
    (h : DequeInv p T s0 s i) (hw : WholeCosts p T W) :
    ∀ j : Nat, j < i → j ≤ p.nbClients →
      (Whole (s.potential 0 j) ∧ 0 ≤ s.potential 0 j ∧
        s.potential 0 j ≤ (j : ℚ) * hopBound p W) ∧
      (1 ≤ j → s.potential 0 j = s.potential 0 (s.pred 0 j) + hop p T (s.pred 0 j) j) := by
  intro j
  induction j using Nat.strong_induction_on with
  | _ j ih =>
    intro hj hjn
    by_cases j0 : j = 0
    · subst j0
      rw [h.zero]
      exact ⟨⟨Whole.zero, le_refl _, by simp⟩, fun g => by omega⟩
    · obtain ⟨w1, w2⟩ := h.written j (by omega) hj
      obtain ⟨⟨a1, a2, a3⟩, _⟩ := ih _ w1 (by omega) (by omega)
      have hb : s.potential 0 (s.pred 0 j) ≤ (p.nbClients : ℚ) * hopBound p W := by
        have h1 : ((s.pred 0 j : Nat) : ℚ) ≤ (p.nbClients : ℚ) := by
          exact_mod_cast (by omega : s.pred 0 j ≤ p.nbClients)
        exact le_trans a3 (mul_le_mul_of_nonneg_right h1 (hopBound_nonneg p W))
      have e := hw.propagate_exact a1 a2 hb w1 hjn
      obtain ⟨c1, c2, c3⟩ := hw.hop_whole w1 hjn
      rw [e] at w2
      refine ⟨⟨by rw [w2]; exact a1.add c1, by rw [w2]; linarith, ?_⟩, fun _ => w2⟩
      rw [w2]
      have a4 : ((s.pred 0 j : Nat) : ℚ) + 1 ≤ (j : ℚ) := by exact_mod_cast w1
      have a5 := mul_le_mul_of_nonneg_right a4 (hopBound_nonneg p W)
      linarith

theorem DequeInv.pot_ok {p : Params} {T : List Int} {W : Nat} {s0 s : Split} {i : Nat}
    (h : DequeInv p T s0 s i) (hw : WholeCosts p T W) : PotOK p W (s.potential 0) i :=
  fun t ht htn => (h.whole hw t ht htn).1

theorem hop_hinge (p : Params) (T : List Int) (pot : Nat → ℚ) (t y : Nat) :
    pot t + hop p T t y =
      hinge p T pot t y + (distTo p T y + p.timeCost (cust T y) 0) := by
  unfold hop hinge base
  ring

/-- On whole costs the value `propagate(t, y, 0)` is exact: it is `hinge t y` plus a
quantity of `y`, a whole number that is not negative and below `2 ^ 35`. -/
theorem WholeCosts.propagate_hinge {p : Params} {T : List Int} {W : Nat}
    (hw : WholeCosts p T W) {sp : Split} (hP : Prepared p T sp)
    (hdur : p.isDurationConstraint = false) {i : Nat} (hpot : PotOK p W (sp.potential 0) i)
    {t y : Nat} (hti : t < i) (hty : t < y) (hy : y ≤ p.nbClients) :
    sp.propagate p t y 0 =
      hinge p T (sp.potential 0) t y + (distTo p T y + p.timeCost (cust T y) 0) ∧
    Whole (sp.propagate p t y 0) ∧ |sp.propagate p t y 0| < 2 ^ 35 := by
  obtain ⟨a1, a2, a3⟩ := hpot t hti (by omega)
  have hb := hpot.le_n hti (by omega)
  have e := hw.propagate_exact a1 a2 hb hty hy
  obtain ⟨c1, c2, c3⟩ := hw.hop_whole hty hy
  rw [propagate_eq hP hdur hty hy 0, e]
  refine ⟨hop_hinge p T _ t y, a1.add c1, ?_⟩
  rw [abs_of_nonneg (by linarith)]
  have h1 := hw.mult_lt (show (p.nbClients : ℚ) + 1 ≤ (p.nbClients : ℚ) + 3 by linarith)
  have : ((p.nbClients : ℚ) + 1) * hopBound p W =
      (p.nbClients : ℚ) * hopBound p W + hopBound p W := by ring
  linarith

/-- The test of the loop that removes the fronts, on whole costs, for any tolerance `E`
between 0 and 1. -/
theorem WholeCosts.front_test {p : Params} {T : List Int} {W : Nat}
    (hw : WholeCosts p T W) {sp : Split} (hP : Prepared p T sp)
    (hdur : p.isDurationConstraint = false) (hE1 : pow2 (-17) ≤ p.EPS) (hE2 : p.EPS ≤ 1)
    {E : ℚ} (hE : 0 < E) (hE' : E ≤ 1) {i : Nat} (hpot : PotOK p W (sp.potential 0) i)
    {f g y : Nat} (hf : f < i) (hg : g < i) (hfy : f < y) (hgy : g < y)
    (hy : y ≤ p.nbClients) :
    sp.propagate p f y 0 > fsub (sp.propagate p g y 0) p.EPS ↔
      hinge p T (sp.potential 0) g y < hinge p T (sp.potential 0) f y + E := by
  obtain ⟨f1, f2, f3⟩ := hw.propagate_hinge hP hdur hpot hf hfy hy
  obtain ⟨g1, g2, g3⟩ := hw.propagate_hinge hP hdur hpot hg hgy hy
  obtain ⟨t1, t2⟩ := tolerance_sub g2 g3 hE1 hE2
  constructor
  · intro h
    have h1 : sp.propagate p g y 0 < sp.propagate p f y 0 + 1 := by linarith
    have h2 := Whole.le_of_lt_add g2 f2 (le_refl _) h1
    rw [f1, g1] at h2
    linarith
  · intro h
    have h1 : sp.propagate p g y 0 < sp.propagate p f y 0 + E := by
      rw [f1, g1]
      linarith
    have h2 := Whole.le_of_lt_add g2 f2 hE' h1
    exact lt_of_lt_of_le t2 h2

/-- The two sides of the tests `dominates` and `dominatesRight` without the last term, on
whole costs: they are exact, and the right side is a whole number that is not negative and
below `2 ^ 35`. -/
theorem WholeCosts.sides {p : Params} {T : List Int} {W : Nat}
    (hw : WholeCosts p T W) {pot : Nat → ℚ} {i : Nat} (hpot : PotOK p W pot (i + 1))
    {e : Nat} (hei : e < i) (hi : i + 1 ≤ p.nbClients) :
    fadd (pot i) (p.timeCost 0 (cust T (i + 1))) = pot i + p.timeCost 0 (cust T (i + 1)) ∧
    Whole (pot i + p.timeCost 0 (cust T (i + 1))) ∧
    fsub (fadd (fadd (pot e) (p.timeCost 0 (cust T (e + 1)))) (distTo p T (i + 1)))
        (distTo p T (e + 1)) =
      pot e + p.timeCost 0 (cust T (e + 1)) + distTo p T (i + 1) - distTo p T (e + 1) ∧
    Whole (pot e + p.timeCost 0 (cust T (e + 1)) + distTo p T (i + 1) - distTo p T (e + 1)) ∧
    0 ≤ pot e + p.timeCost 0 (cust T (e + 1)) + distTo p T (i + 1) - distTo p T (e + 1) ∧
    pot e + p.timeCost 0 (cust T (e + 1)) + distTo p T (i + 1) - distTo p T (e + 1) ≤
      ((p.nbClients : ℚ) + 1) * hopBound p W := by
  obtain ⟨a1, a2, a3⟩ := hpot i (by omega) (by omega)
  obtain ⟨b1, b2, b3⟩ := hpot e (by omega) (by omega)
  have ha := hpot.le_n (show i < i + 1 by omega) (by omega)
  have hb := hpot.le_n (show e < i + 1 by omega) (by omega)
  obtain ⟨d1, d2, d3⟩ := hw.dist_sum (i + 1) hi
  obtain ⟨e1, e2, e3⟩ := hw.dist_sum (e + 1) (by omega)
  have hm := hw.dist_mono (e + 1) (i - e) (by omega)
  rw [show e + 1 + (i - e) = i + 1 by omega] at hm
  have hdl := hw.dist_le hi
  obtain ⟨x1, x2, x3⟩ := hw.dist_whole 0 (cust T (i + 1))
  obtain ⟨y1, y2, y3⟩ := hw.dist_whole 0 (cust T (e + 1))
  have hwn := hw.W_nonneg
  have hB : hopBound p W = (p.nbClients : ℚ) * (W : ℚ) + 3 * (W : ℚ) := by
    unfold hopBound; ring
  have hn0 : (0 : ℚ) ≤ (p.nbClients : ℚ) := Nat.cast_nonneg _
  have hU : ∀ z : ℚ, 0 ≤ z → z ≤ (p.nbClients : ℚ) * hopBound p W + hopBound p W →
      |z| ≤ 2 ^ 53 := by
    intro z z0 z1
    refine hw.exact z0 ?_
    have : ((p.nbClients : ℚ) + 3) * hopBound p W =
        (p.nbClients : ℚ) * hopBound p W + 3 * hopBound p W := by ring
    have := hopBound_nonneg p W
    linarith
  have s0 : fadd (pot i) (p.timeCost 0 (cust T (i + 1))) =
      pot i + p.timeCost 0 (cust T (i + 1)) :=
    fadd_whole a1 x1 (hU _ (by linarith) (by linarith))
  have s1 : fadd (pot e) (p.timeCost 0 (cust T (e + 1))) =
      pot e + p.timeCost 0 (cust T (e + 1)) :=
    fadd_whole b1 y1 (hU _ (by linarith) (by linarith))
  have s2 : fadd (pot e + p.timeCost 0 (cust T (e + 1))) (distTo p T (i + 1)) =
      pot e + p.timeCost 0 (cust T (e + 1)) + distTo p T (i + 1) :=
    fadd_whole (b1.add y1) d1 (hU _ (by linarith) (by linarith))
  have s3 : fsub (pot e + p.timeCost 0 (cust T (e + 1)) + distTo p T (i + 1))
      (distTo p T (e + 1)) =
      pot e + p.timeCost 0 (cust T (e + 1)) + distTo p T (i + 1) - distTo p T (e + 1) :=
    fsub_whole ((b1.add y1).add d1) e1 (hU _ (by linarith) (by linarith))
  refine ⟨s0, a1.add x1, by rw [s1, s2, s3], ((b1.add y1).add d1).sub e1, by linarith, ?_⟩
  have : ((p.nbClients : ℚ) + 1) * hopBound p W =
      (p.nbClients : ℚ) * hopBound p W + hopBound p W := by ring
  linarith

/-- The test `dominatesRight` on whole costs, for any tolerance `E` between 0 and 1. -/
theorem WholeCosts.dominatesRight_iff {p : Params} {T : List Int} {W : Nat}
    (hw : WholeCosts p T W) {sp : Split} (hP : Prepared p T sp)
    (hE1 : pow2 (-17) ≤ p.EPS) (hE2 : p.EPS ≤ 1) {E : ℚ} (hE : 0 < E) (hE' : E ≤ 1)
    {i : Nat} (hpot : PotOK p W (sp.potential 0) (i + 1)) {e : Nat} (hei : e < i)
    (hi : i + 1 ≤ p.nbClients) :
    sp.dominatesRight p e i 0 = true ↔
      base p T (sp.potential 0) i < base p T (sp.potential 0) e + E := by
  obtain ⟨s0, w0, s3, w3, n3, b3⟩ := hw.sides hpot hei hi
  unfold dominatesRight
  rw [decide_eq_true_iff, hP.dist (i + 1) hi, hP.dist (e + 1) (by omega),
    hP.cli (i + 1) (by omega) hi, hP.cli (e + 1) (by omega) (by omega)]
  simp only [client]
  rw [s0, s3]
  have hlt : |sp.potential 0 e + p.timeCost 0 (cust T (e + 1)) + distTo p T (i + 1) -
      distTo p T (e + 1)| < 2 ^ 35 := by
    rw [abs_of_nonneg n3]
    exact lt_of_le_of_lt b3 (hw.mult_lt (by linarith))
  obtain ⟨t1, t2⟩ := tolerance_add w3 hlt hE1 hE2
  unfold base
  constructor
  · intro h
    have h1 := Whole.le_of_lt_add w0 w3 (le_refl _) (lt_of_lt_of_le h t2)
    linarith
  · intro h
    have h1 := Whole.le_of_lt_add w0 w3 hE' (by linarith)
    exact lt_of_le_of_lt h1 t1

/-- The test `dominates` on whole costs. -/
theorem WholeCosts.dominates_iff {p : Params} {T : List Int} {W : Nat}
    (hw : WholeCosts p T W) {sp : Split} (hP : Prepared p T sp)
    {i : Nat} (hpot : PotOK p W (sp.potential 0) (i + 1)) {e : Nat} (hei : e < i)
    (hi : i + 1 ≤ p.nbClients) :
    sp.dominates p e i 0 = true ↔
      base p T (sp.potential 0) e +
        p.penaltyCapacity * (loadTo p T i - loadTo p T e) < base p T (sp.potential 0) i := by
  obtain ⟨s0, w0, s3, w3, n3, b3⟩ := hw.sides hpot hei hi
  obtain ⟨l1, l2, l3, l4, l5, l6⟩ := hw.load_diff (le_of_lt hei) (show i ≤ p.nbClients by omega)
  have hpc := hw.pen_nonneg
  have hp0 : 0 ≤ p.penaltyCapacity * (loadTo p T i - loadTo p T e) := mul_nonneg hpc l3
  have hwn := hw.W_nonneg
  have hWle := hw.W_le
  have s4 : fadd (sp.potential 0 e + p.timeCost 0 (cust T (e + 1)) + distTo p T (i + 1) -
      distTo p T (e + 1)) (p.penaltyCapacity * (loadTo p T i - loadTo p T e)) =
      sp.potential 0 e + p.timeCost 0 (cust T (e + 1)) + distTo p T (i + 1) -
        distTo p T (e + 1) + p.penaltyCapacity * (loadTo p T i - loadTo p T e) := by
    refine fadd_whole w3 (hw.pen_whole_coef.mul l2) (hw.exact (by linarith) ?_)
    have : ((p.nbClients : ℚ) + 3) * hopBound p W =
        ((p.nbClients : ℚ) + 1) * hopBound p W + 2 * hopBound p W := by ring
    have := hopBound_nonneg p W
    linarith
  unfold dominates
  rw [decide_eq_true_iff, hP.dist (i + 1) hi, hP.dist (e + 1) (by omega),
    hP.cli (i + 1) (by omega) hi, hP.cli (e + 1) (by omega) (by omega),
    hP.load i (by omega), hP.load e (by omega)]
  simp only [client]
  rw [s0, s3, l1, l6, s4]
  unfold base
  constructor <;> intro h <;> linarith

end Split
namespace Split

/-- The loop that removes the fronts leaves a queue in order whose front is better than
its successor for the next position. -/
theorem pop_front_loop_ok {p : Params} {T : List Int} {W : Nat} (hw : WholeCosts p T W)
    {sp : Split} (hP : Prepared p T sp) (hdur : p.isDurationConstraint = false)
    (hE1 : pow2 (-17) ≤ p.EPS) (hE2 : p.EPS ≤ 1) {E : ℚ} (hE : 0 < E) (hE' : E ≤ 1)
    {j : Nat} (hj : j + 1 ≤ p.nbClients) (hpot : PotOK p W (sp.potential 0) (j + 1)) :
    ∀ (m : Nat) (q : Trivial_Deque), QueueOK p T E (sp.potential 0) q (j + 1) → q.size ≤ m →
    QueueOK p T E (sp.potential 0) (pop_front_loop p sp 0 j m q) (j + 1) ∧
    FrontOK p T E (sp.potential 0) (pop_front_loop p sp 0 j m q) (j + 1)
  | 0, q, h, hm => by
    exfalso
    have := h.nonempty
    have e : q.size = q.indexBack - q.indexFront + 1 := rfl
    rw [e] at hm
    have : ((0 : Nat) : Int) = 0 := rfl
    omega
  | m + 1, q, h, hm => by
    have e : q.size = q.indexBack - q.indexFront + 1 := rfl
    have hfa : q.get_front = q.myDeque q.indexFront := rfl
    have hfb : q.get_next_front = q.myDeque (q.indexFront + 1) := rfl
    have hmono : ∀ a b, a ≤ b → b ≤ p.nbClients → loadTo p T a ≤ loadTo p T b :=
      fun a b hab hb => hw.loads_mono hab hb
    unfold pop_front_loop
    by_cases c : 1 < q.size ∧
        sp.propagate p q.get_front (j + 1) 0 >
          fsub (sp.propagate p q.get_next_front (j + 1) 0) p.EPS
    · rw [if_pos c]
      obtain ⟨c1, c2⟩ := c
      rw [e] at c1
      have l1 := h.lt q.indexFront (le_refl _) (by omega)
      have l2 := h.lt (q.indexFront + 1) (by omega) (by omega)
      rw [hfa, hfb, hw.front_test hP hdur hE1 hE2 hE hE' hpot l1 l2 l1 l2 hj] at c2
      have h2 := h.pop_front_ok (le_of_lt hE) hw.pen_nonneg hmono hj (by omega)
        (by rw [hfa, hfb]; exact c2)
      refine pop_front_loop_ok hw hP hdur hE1 hE2 hE hE' hj hpot m q.pop_front h2 ?_
      have e4 : q.pop_front.size = q.indexBack - (q.indexFront + 1) + 1 := rfl
      rw [e4]
      rw [e] at hm
      push_cast at hm
      omega
    · rw [if_neg c]
      refine ⟨h, fun hlt => ?_⟩
      have l1 := h.lt q.indexFront (le_refl _) (by omega)
      have l2 := h.lt (q.indexFront + 1) (by omega) (by omega)
      have c2 : ¬ sp.propagate p q.get_front (j + 1) 0 >
          fsub (sp.propagate p q.get_next_front (j + 1) 0) p.EPS := by
        intro g
        exact c ⟨by rw [e]; omega, g⟩
      rw [hfa, hfb, hw.front_test hP hdur hE1 hE2 hE hE' hpot l1 l2 l1 l2 hj] at c2
      rw [hfa, hfb]
      exact not_lt.1 c2

/-- The first part of the update of the queue at position `i`: `i` enters the queue unless
the back dominates it, after the backs it dominates from the right have left. The state of
the queue is kept, now for position `i + 1`. -/
theorem QueueOK.push_ok {p : Params} {T : List Int} {W : Nat} (hw : WholeCosts p T W)
    {sp : Split} (hP : Prepared p T sp)
    (hE1 : pow2 (-17) ≤ p.EPS) (hE2 : p.EPS ≤ 1) {E : ℚ} (hE0 : 0 < E) (hE' : E ≤ 1)
    {i : Nat} (hi : i + 1 ≤ p.nbClients) (hpot : PotOK p W (sp.potential 0) (i + 1))
    {q : Trivial_Deque} (h : QueueOK p T E (sp.potential 0) q i) :
    QueueOK p T E (sp.potential 0)
      (if sp.dominates p q.get_back i 0 = false then
        (pop_back_loop p sp 0 i q.size.toNat q).push_back i else q) (i + 1) := by
  have hE : 0 ≤ E := le_of_lt hE0
  have ha := hw.pen_nonneg
  have hmono : ∀ a b, a ≤ b → b ≤ p.nbClients → loadTo p T a ≤ loadTo p T b :=
    fun a b hab hb => hw.loads_mono hab hb
  have hback : q.get_back = q.myDeque q.indexBack := rfl
  have hne := h.nonempty
  have hfn := h.front_nonneg
  have hbl := h.back_le
  have hcast : (((i + 1 : Nat) : ℚ)) = (i : ℚ) + 1 := by push_cast; ring
  have hcastz : (((i + 1 : Nat) : Int)) = (i : Int) + 1 := by push_cast; ring
  have hfq : (0 : ℚ) ≤ (q.indexFront : ℚ) := by exact_mod_cast hfn
  have hi0 : (0 : ℚ) ≤ (i : ℚ) := Nat.cast_nonneg _
  have hdelta : ((i : ℚ) - 1 + (q.indexFront : ℚ)) * E ≤
      (((i + 1 : Nat) : ℚ) - 1 + (q.indexFront : ℚ)) * E := by
    rw [hcast]
    exact mul_le_mul_of_nonneg_right (by linarith) hE
  have hdelta0 : 0 ≤ (((i + 1 : Nat) : ℚ) - 1 + (q.indexFront : ℚ)) * E := by
    rw [hcast]
    exact mul_nonneg (by linarith) hE
  have hbi := h.lt q.indexBack hne (le_refl _)
  by_cases c : sp.dominates p q.get_back i 0 = false
  · rw [if_pos c]
    have hsz : q.size ≤ (q.size.toNat : Int) := by
      rw [Int.toNat_of_nonneg]
      have e : q.size = q.indexBack - q.indexFront + 1 := rfl
      omega
    obtain ⟨a1, a2, a3, a4, a5, a6⟩ := pop_back_loop_stop p sp 0 i q.size.toNat q (by omega) hsz
    generalize pop_back_loop p sp 0 i q.size.toNat q = r at a1 a2 a3 a4 a5 a6 ⊢
    have e1 : (r.push_back i).indexFront = q.indexFront := a1
    have e2 : (r.push_back i).indexBack = r.indexBack + 1 := rfl
    have e3 : (r.push_back i).myDeque = upd q.myDeque (r.indexBack + 1) i := by
      show upd r.myDeque (r.indexBack + 1) i = _
      rw [a2]
    have hnd : ¬ sp.dominates p q.get_back i 0 = true := by rw [c]; simp
    rw [hback, hw.dominates_iff hP hpot hbi hi] at hnd
    have hold : ∀ u, u ≤ r.indexBack → (r.push_back i).myDeque u = q.myDeque u := by
      intro u hu
      rw [e3, upd_other _ _ _ _ (by omega)]
    have hnew : (r.push_back i).myDeque (r.indexBack + 1) = i := by
      rw [e3, upd_same]
    refine ⟨by rw [e1, e2]; omega, by rw [e1]; exact hfn, by rw [e2, hcastz]; omega,
      fun u h1 h2 => ?_, fun u h1 h2 => ?_, fun t ht => ?_⟩
    · rw [e1] at h1
      rw [e2] at h2
      by_cases eu : u = r.indexBack + 1
      · rw [eu, hnew]; omega
      · rw [hold u (by omega)]
        have := h.lt u h1 (by omega)
        omega
    · rw [e1] at h1
      rw [e2] at h2
      by_cases eu : u = r.indexBack
      · subst eu
        rw [hold _ (le_refl _), hnew]
        have hdr := a6 h1
        have hdr2 : ¬ sp.dominatesRight p (q.myDeque r.indexBack) i 0 = true := by
          rw [hdr]; simp
        have hlt := h.lt r.indexBack h1 a3
        rw [hw.dominatesRight_iff hP hE1 hE2 hE0 hE' hpot hlt hi] at hdr2
        obtain ⟨b1, b2, b3⟩ := h.between hE h1 a3 (le_refl _)
        have hL := hmono _ _ b1 (by omega : q.myDeque q.indexBack ≤ p.nbClients)
        have hL2 := hmono _ _ (le_of_lt hbi) (by omega : i ≤ p.nbClients)
        have hmul : p.penaltyCapacity *
            (loadTo p T (q.myDeque q.indexBack) - loadTo p T (q.myDeque r.indexBack)) +
            p.penaltyCapacity * (loadTo p T i - loadTo p T (q.myDeque q.indexBack)) =
            p.penaltyCapacity * (loadTo p T i - loadTo p T (q.myDeque r.indexBack)) := by ring
        refine ⟨hlt, by linarith, by linarith⟩
      · rw [hold u (by omega), hold (u + 1) (by omega)]
        exact h.incr u h1 (by omega)
    · rw [e1, e2]
      by_cases et : t = i
      · subst et
        refine ⟨r.indexBack + 1, by omega, le_refl _, fun y y1 y2 => ?_⟩
        rw [hnew]
        linarith
      · obtain ⟨u, u1, u2, u3⟩ := h.cover t (by omega)
        by_cases eu : u ≤ r.indexBack
        · refine ⟨u, u1, by omega, fun y y1 y2 => ?_⟩
          rw [hold u eu]
          have := u3 y (by omega) y2
          linarith
        · refine ⟨r.indexBack + 1, by omega, le_refl _, fun y y1 y2 => ?_⟩
          rw [hnew]
          have hdr := a5 u (by omega) u2
          have hlt := h.lt u u1 u2
          rw [hw.dominatesRight_iff hP hE1 hE2 hE0 hE' hpot hlt hi] at hdr
          have hL := hmono _ _ (le_of_lt hlt) (by omega : i ≤ p.nbClients)
          have h2 := hinge_le_base p T (sp.potential 0) ha hL y
          have := u3 y (by omega) y2
          have hd : (((i + 1 : Nat) : ℚ) - 1 + (q.indexFront : ℚ)) * E =
              ((i : ℚ) - 1 + (q.indexFront : ℚ)) * E + E := by
            rw [hcast]; ring
          rw [hd]
          linarith
  · rw [if_neg c]
    have hd : sp.dominates p q.get_back i 0 = true := by simpa using c
    rw [hback, hw.dominates_iff hP hpot hbi hi] at hd
    refine ⟨hne, hfn, by rw [hcastz]; omega, fun u h1 h2 => ?_, h.incr, fun t ht => ?_⟩
    · have := h.lt u h1 h2
      omega
    · by_cases et : t = i
      · subst et
        refine ⟨q.indexBack, hne, le_refl _, fun y y1 y2 => ?_⟩
        have hL := hmono _ _ (le_of_lt hbi) (by omega : t ≤ p.nbClients)
        have h2 := hinge_ge_base p T (sp.potential 0) ha hL y
        linarith
      · obtain ⟨u, u1, u2, u3⟩ := h.cover t (by omega)
        refine ⟨u, u1, u2, fun y y1 y2 => ?_⟩
        have := u3 y (by omega) y2
        linarith

/-- The update of the queue at position `i` keeps the state of the queue and leaves a front
that is better than its successor for position `i + 1`. -/
theorem update_queue_ok {p : Params} {T : List Int} {W : Nat} (hw : WholeCosts p T W)
    {sp : Split} (hP : Prepared p T sp) (hdur : p.isDurationConstraint = false)
    (hE1 : pow2 (-17) ≤ p.EPS) (hE2 : p.EPS ≤ 1) {E : ℚ} (hE : 0 < E) (hE' : E ≤ 1)
    {i : Nat} (hi : i + 1 ≤ p.nbClients) (hpot : PotOK p W (sp.potential 0) (i + 1))
    {q : Trivial_Deque} (h : QueueOK p T E (sp.potential 0) q i) :
    QueueOK p T E (sp.potential 0) (update_queue p 0 sp q i) (i + 1) ∧
    FrontOK p T E (sp.potential 0) (update_queue p 0 sp q i) (i + 1) := by
  have h1 := h.push_ok hw hP hE1 hE2 hE hE' hi hpot
  unfold update_queue
  simp only
  generalize (if sp.dominates p q.get_back i 0 = false then
      (pop_back_loop p sp 0 i q.size.toNat q).push_back i else q) = q1 at h1 ⊢
  refine pop_front_loop_ok hw hP hdur hE1 hE2 hE hE' hi hpot q1.size.toNat q1 h1 ?_
  rw [Int.toNat_of_nonneg]
  have e : q1.size = q1.indexBack - q1.indexFront + 1 := rfl
  have := h1.nonempty
  omega

end Split
namespace Split

/-- The loop of the linear algorithm of `splitSimple` on whole costs: the potential
written at each position is at most the potential of any earlier position plus the cost of
the route between them, plus twice the tolerance `E` for each earlier position. -/
theorem deque_opt_loop {p : Params} {T : List Int} {W : Nat} (hw : WholeCosts p T W)
    (hdur : p.isDurationConstraint = false)
    (hE1 : pow2 (-17) ≤ p.EPS) (hE2 : p.EPS ≤ 1) {E : ℚ} (hE : 0 < E) (hE' : E ≤ 1)
    {s0 : Split} :
    ∀ (m i : Nat) (s : Split) (q : Trivial_Deque), DequeInv p T s0 s i → 1 ≤ i →
    i + m = p.nbClients + 1 →
    (i ≤ p.nbClients →
      QueueOK p T E (s.potential 0) q i ∧ FrontOK p T E (s.potential 0) q i) →
    (∀ j, 1 ≤ j → j < i → ∀ t, t < j →
      s.potential 0 j ≤ s.potential 0 t + hop p T t j + 2 * ((j : ℚ) - 1) * E) →
    ∀ j, 1 ≤ j → j ≤ p.nbClients → ∀ t, t < j →
      (deque_loop_simple p m i s q).potential 0 j ≤
        (deque_loop_simple p m i s q).potential 0 t + hop p T t j +
          2 * ((j : ℚ) - 1) * E
  | 0, i, s, q, h, _, hm, _, hres => by
    intro j j1 j2 t tj
    exact hres j j1 (by omega) t tj
  | m + 1, i, s, q, h, hi1, hm, hq, hres => by
    have hin : i ≤ p.nbClients := by omega
    have hmono : ∀ a b, a ≤ b → b ≤ p.nbClients → loadTo p T a ≤ loadTo p T b :=
      fun a b hab hb => hw.loads_mono hab hb
    obtain ⟨hq1, hq2⟩ := hq hin
    have hall : q.All (fun d => d < i) := ⟨hq1.nonempty, fun u u1 u2 => hq1.lt u u1 u2⟩
    obtain ⟨a1, a2⟩ := h.deque_step_inv hdur hi1 hin hall
    obtain ⟨f1, f2, f3, f4, f5, f6, f7⟩ := write_front_fields p 0 0 s q i
    have hstep1 : (deque_step p 0 0 s q i).1 = write_front p 0 0 s q i :=
      (deque_step_spec p 0 0 s q i hall).1
    have hfront : q.get_front < i := hall.front
    have hpot : ∀ t, t ≠ i → (write_front p 0 0 s q i).potential 0 t = s.potential 0 t := by
      intro t ht
      rw [f1, upd2_other _ _ _ _ _ _ (fun g => ht g.2)]
    have hpoti : (write_front p 0 0 s q i).potential 0 i =
        hinge p T (s.potential 0) q.get_front i + (distTo p T i + p.timeCost (cust T i) 0) := by
      rw [f1, upd2_same]
      exact (hw.propagate_hinge h.prepared hdur (h.pot_ok hw) hfront hfront hin).1
    unfold deque_loop_simple
    refine deque_opt_loop hw hdur hE1 hE2 hE hE' m (i + 1) _ _ a1 (by omega) (by omega)
      (fun hi2 => ?_) (fun j j1 j2 t tj => ?_)
    · have hP2 : Prepared p T (write_front p 0 0 s q i) := by
        rw [← hstep1]
        exact a1.prepared
      have hpot2 : PotOK p W ((write_front p 0 0 s q i).potential 0) (i + 1) := by
        rw [← hstep1]
        exact a1.pot_ok hw
      have hq3 : QueueOK p T E ((write_front p 0 0 s q i).potential 0) q i :=
        hq1.congr (fun t ht => hpot t (by omega))
      have hu := update_queue_ok hw hP2 hdur hE1 hE2 hE hE' hi2 hpot2 hq3
      have e2 : (deque_step p 0 0 s q i).2 =
          update_queue p 0 (write_front p 0 0 s q i) q i := by
        unfold deque_step
        rw [if_pos (by omega)]
      rw [e2, hstep1]
      exact hu
    · rw [hstep1]
      by_cases ej : j = i
      · subst ej
        rw [hpoti, hpot t (by omega)]
        obtain ⟨u, u1, u2, u3⟩ := hq1.cover t tj
        have c1 := u3 j (le_refl _) hin
        have c2 := hq1.front_best hq2 hE hw.pen_nonneg hmono hin u u1 u2
        have c3 := hop_hinge p T (s.potential 0) t j
        have c4 : ((j : ℚ) - 1 + (q.indexFront : ℚ)) * E ≤ 2 * ((j : ℚ) - 1) * E := by
          have b1 := hq1.back_le
          have b2 := hq1.nonempty
          have b3 : q.indexFront ≤ (j : Int) - 1 := by omega
          have b4 : (q.indexFront : ℚ) ≤ (j : ℚ) - 1 := by exact_mod_cast b3
          exact mul_le_mul_of_nonneg_right (by linarith) (le_of_lt hE)
        linarith
      · rw [hpot j ej, hpot t (by omega)]
        exact hres j j1 (by omega) t tj

theorem create_queue_ok (p : Params) (T : List Int) (E : ℚ) (pot : Nat → ℚ) :
    QueueOK p T E pot (Trivial_Deque.create 0) 1 ∧
    FrontOK p T E pot (Trivial_Deque.create 0) 1 := by
  have e1 : (Trivial_Deque.create 0).indexFront = 0 := rfl
  have e2 : (Trivial_Deque.create 0).indexBack = 0 := rfl
  have e3 : (Trivial_Deque.create 0).myDeque 0 = 0 := by simp [Trivial_Deque.create, upd]
  refine ⟨⟨by rw [e1, e2], by rw [e1], by rw [e2]; simp, fun u h1 h2 => ?_, fun u h1 h2 => ?_,
    fun t ht => ?_⟩, fun g => ?_⟩
  · rw [e1] at h1
    rw [e2] at h2
    have : u = 0 := by omega
    subst this
    rw [e3]
    omega
  · rw [e1] at h1
    rw [e2] at h2
    omega
  · have : t = 0 := by omega
    subst this
    refine ⟨0, by rw [e1], by rw [e2], fun y _ _ => ?_⟩
    rw [e1, e3]
    simp
  · rw [e1, e2] at g
    omega

/-- The linear algorithm of `splitSimple` against the Bellman recurrence, on whole costs
and for a tolerance between `2 ^ (-17)` and 1: the potential of each position of the tour
is at most the value that `propagate` gives from any earlier position. -/
theorem deque_optimal {p : Params} {T : List Int} {W : Nat} (hw : WholeCosts p T W)
    (hdur : p.isDurationConstraint = false)
    (hE1 : pow2 (-17) ≤ p.EPS) (hE2 : p.EPS ≤ 1) {sp : Split} (hP : Prepared p T sp) :
    ∀ j, 1 ≤ j → j ≤ p.nbClients → ∀ t, t < j →
      (simple_potentials p sp).potential 0 j ≤
        propagateFrom p T ((simple_potentials p sp).potential 0 t) t j := by
  intro j j1 j2 t tj
  have hD := deque_final hdur hP
  have hpot := hD.pot_ok hw
  have hn : (1 : ℚ) ≤ (p.nbClients : ℚ) := by exact_mod_cast (by omega : 1 ≤ p.nbClients)
  have hE : (0 : ℚ) < 1 / (2 * (p.nbClients : ℚ)) := by positivity
  have hE' : 1 / (2 * (p.nbClients : ℚ)) ≤ 1 := by
    rw [div_le_one (by positivity)]
    linarith
  have key : (simple_potentials p sp).potential 0 j ≤
      (simple_potentials p sp).potential 0 t + hop p T t j +
        2 * ((j : ℚ) - 1) * (1 / (2 * (p.nbClients : ℚ))) := by
    rw [simple_potentials_lin p sp hdur]
    exact deque_opt_loop hw hdur hE1 hE2 hE hE' p.nbClients 1 _ _ (DequeInv.deque_init hP)
      (le_refl _) (by omega) (fun _ => create_queue_ok p T _ _) (fun j j1 j2 => by omega)
      j j1 j2 t tj
  obtain ⟨a1, a2, a3⟩ := hpot t (by omega) (by omega)
  obtain ⟨b1, b2, b3⟩ := hpot j (by omega) j2
  obtain ⟨c1, c2, c3⟩ := hw.hop_whole tj j2
  rw [hw.propagate_exact a1 a2 (hpot.le_n (by omega) (by omega)) tj j2]
  refine Whole.le_of_lt_add b1 (a1.add c1) (le_refl _) ?_
  have hj : (j : ℚ) ≤ (p.nbClients : ℚ) := by exact_mod_cast j2
  have hlt : 2 * ((j : ℚ) - 1) * (1 / (2 * (p.nbClients : ℚ))) < 1 := by
    rw [mul_one_div, div_lt_one (by positivity)]
    linarith
  linarith

end Split
theorem Split.create_base (p : Params) : Split.Base (Split.create p) :=
  ⟨rfl, rfl, rfl, rfl, fun _ _ => Nat.zero_le _⟩

theorem flatten_unique (R : Nat → List Int) : ∀ (N : Nat),
    ((List.range N).map R).flatten.Nodup → ∀ k k2, k < N → k2 < N → ∀ c, c ∈ R k → c ∈ R k2 →
    k = k2 := by
  intro N hnd k k2 hk hk2 c hc hc2
  rw [List.nodup_flatten] at hnd
  have hp := hnd.2
  rw [List.pairwise_map] at hp
  by_contra hne
  rcases Nat.lt_or_gt_of_ne hne with h | h
  · have := List.pairwise_iff_getElem.1 hp k k2 (by simpa using hk) (by simpa using hk2) h
    simp only [List.getElem_range] at this
    exact this hc hc2
  · have := List.pairwise_iff_getElem.1 hp k2 k (by simpa using hk2) (by simpa using hk) h
    simp only [List.getElem_range] at this
    exact this hc2 hc

theorem linearParams_ceil :
    Split.ceil_div linearParams.totalDemand linearParams.vehicleCapacity = some 3 := by
  decide!

/-- C26: for every giant tour `T` (a list of `nbClients` distinct customers), every
`nbMaxVehicles` for which the number of vehicles used by Split is at most `nbVehicles`, and
every state of the `Split` object, in the arithmetic of type `double` (without duration
constraint, with the sentinel `1.e30` above the costs that level 0 of the linear algorithm
compares it with): when `generalSplit` completes without throwing, the routes written to
`chromR`, concatenated in the order of their indices, are exactly the giant tour, the tour
itself is unchanged, and every customer of the tour is in exactly one route. -/
theorem general_split_concat (p : Params) (sp : Split) (hbase : Split.Base sp) (T : List Int)
    (hT : T.length = p.nbClients) (hnd : T.Nodup)
    (h0 : p.isDurationConstraint = false → Split.SmallL0 p T) (nbMaxVehicles : Int)
    (hK : ∀ lower, Split.ceil_div p.totalDemand p.vehicleCapacity = some lower →
      (max nbMaxVehicles lower).toNat ≤ p.nbVehicles)
    (R : Nat → List Int) (r : Split × Individual)
    (hr : Split.generalSplit p sp ⟨T, R⟩ nbMaxVehicles = some r) :
    ((List.range p.nbVehicles).map r.2.chromR).flatten = T ∧ r.2.chromT = T ∧
    ∀ c ∈ T, ∃ k, k < p.nbVehicles ∧ c ∈ r.2.chromR k ∧
      ∀ k2, k2 < p.nbVehicles → c ∈ r.2.chromR k2 → k2 = k := by
  obtain ⟨h1, h2⟩ := Split.generalSplit_spec hbase hT h0 nbMaxVehicles hK R hr
  refine ⟨h2, h1, fun c hc => ?_⟩
  have hc2 : c ∈ ((List.range p.nbVehicles).map r.2.chromR).flatten := by rw [h2]; exact hc
  rw [List.mem_flatten] at hc2
  obtain ⟨l, hl, hcl⟩ := hc2
  rw [List.mem_map] at hl
  obtain ⟨k, hk, rfl⟩ := hl
  have hk2 : k < p.nbVehicles := List.mem_range.1 hk
  refine ⟨k, hk2, hcl, fun k2 h3 h4 => ?_⟩
  exact flatten_unique r.2.chromR p.nbVehicles (by rw [h2]; exact hnd) k2 k h3 hk2 c h4 hcl

theorem general_split_concat_witness :
    ((List.range linearParams.nbVehicles).map
      ((Split.generalSplit linearParams (Split.create linearParams) guardIndiv 2).get
        (by decide!)).2.chromR).flatten = [1, 2, 3] ∧
    ((Split.generalSplit linearParams (Split.create linearParams) guardIndiv 2).get
      (by decide!)).2.chromT = [1, 2, 3] ∧
    ∀ c ∈ [(1 : Int), 2, 3], ∃ k, k < linearParams.nbVehicles ∧
      c ∈ ((Split.generalSplit linearParams (Split.create linearParams) guardIndiv 2).get
        (by decide!)).2.chromR k ∧
      ∀ k2, k2 < linearParams.nbVehicles →
        c ∈ ((Split.generalSplit linearParams (Split.create linearParams) guardIndiv 2).get
          (by decide!)).2.chromR k2 → k2 = k :=
  general_split_concat linearParams (Split.create linearParams)
    (Split.create_base linearParams) [1, 2, 3] (by decide) (by decide)
    (fun _ => by decide!) 2
    (fun lower h => by
      rw [linearParams_ceil] at h
      cases h
      decide)
    (fun _ => []) _ (Option.some_get _).symm

theorem guardParams_small : ∀ j, j ≤ guardParams.nbClients →
    Split.singlesTo guardParams [1, 2, 3] j < Split.INF := by
  intro j hj
  have h2 : j ≤ 3 := hj
  interval_cases j <;> decide!

/-- C28, counterexample: in `guardParams` (demands 2, 2, 1, capacity 2, penalty 1 per unit
of excess load, customers at distance 100 from the depot and 1 from each other) the inner
loop of the Bellman algorithm stops after two customers, whose load 4 exceeds 1.5 times the
capacity, so that the route serving all three customers is never tried: the potential of
position 3 is 402, the cost of the best split into two routes, while the single route
costs 205. In `tenthParams`, where the only route has the distance `0.1 + 0.2` and no
penalty, the potential of position 1 is this sum rounded to the type `double`, which is
not the sum. -/
theorem simple_bellman_not_min :
    guardParams.isDurationConstraint = true ∧
    (Split.simple_potentials guardParams
      (Split.prepare guardParams [1, 2, 3] (Split.create guardParams))).potential 0 3 = 402 ∧
    Split.cutCost guardParams [1, 2, 3] 0 [3] = 205 ∧
    tenthParams.isDurationConstraint = true ∧
    (Split.simple_potentials tenthParams
      (Split.prepare tenthParams [1] (Split.create tenthParams))).potential 0 1 =
      binary64 (tenthParams.timeCost 0 1 + tenthParams.timeCost 1 0) ∧
    (Split.simple_potentials tenthParams
      (Split.prepare tenthParams [1] (Split.create tenthParams))).potential 0 1 ≠
      tenthParams.timeCost 0 1 + tenthParams.timeCost 1 0 := by
  refine ⟨by decide, by decide!, by decide!, by decide, by decide!, by decide!⟩

/-- C28, amended: in `splitSimple` with the duration constraint, for every tour, every
state of the `Split` object and every position `i` of the tour, when the capacity is not
negative and the sentinel `1.e30` is above the cost of the one-customer routes:
`potential[0][i]` is the minimum, over all ways of cutting the first `i` positions into
consecutive routes in which the load of every proper initial part of a route is at most
1.5 times the capacity, of the sum per route of its distance plus the penalties of its
excess load and of its excess duration, each route cost and the sum over the routes being
computed in the arithmetic of type `double`, in the order of the source: some such cut has
this cost and none is cheaper. -/
theorem simple_bellman_min (p : Params) (sp : Split) (hbase : Split.Base sp) (T : List Int)
    (hdur : p.isDurationConstraint = true) (hQ : 0 ≤ p.vehicleCapacity)
    (hsmall : ∀ j, j ≤ p.nbClients → Split.singlesTo p T j < Split.INF) (i : Nat) (h1 : 1 ≤ i)
    (hi : i ≤ p.nbClients) :
    (∃ lens : List Nat, Split.GuardedCut p T 0 lens ∧ lens.sum = i ∧
      Split.cutCost p T 0 lens =
        (Split.simple_potentials p (Split.prepare p T sp)).potential 0 i) ∧
    (∀ lens : List Nat, Split.GuardedCut p T 0 lens → lens.sum = i →
      (Split.simple_potentials p (Split.prepare p T sp)).potential 0 i ≤
        Split.cutCost p T 0 lens) := by
  obtain ⟨q1, _⟩ := Split.prepare_spec p T sp hbase
  have hB := Split.bellman_final hdur q1
  refine ⟨(hB.attained hQ hsmall i hi).lens, fun lens hg hs => ?_⟩
  have := Split.Path.of_lens lens hg (by omega)
  rw [hs] at this
  exact hB.optimal this

theorem simple_bellman_min_witness :
    (∃ lens : List Nat, Split.GuardedCut guardParams [1, 2, 3] 0 lens ∧ lens.sum = 3 ∧
      Split.cutCost guardParams [1, 2, 3] 0 lens =
        (Split.simple_potentials guardParams
          (Split.prepare guardParams [1, 2, 3] (Split.create guardParams))).potential 0 3) ∧
    (∀ lens : List Nat, Split.GuardedCut guardParams [1, 2, 3] 0 lens → lens.sum = 3 →
      (Split.simple_potentials guardParams
        (Split.prepare guardParams [1, 2, 3] (Split.create guardParams))).potential 0 3 ≤
        Split.cutCost guardParams [1, 2, 3] 0 lens) :=
  simple_bellman_min guardParams (Split.create guardParams) (Split.create_base guardParams)
    [1, 2, 3] (by decide) (by decide) guardParams_small 3 (by decide) (by decide)

theorem linearParams_costs : ∀ k : Nat, k < linearParams.nbClients →
    ∀ b, b ≤ linearParams.nbClients → ∀ a, a < b →
    Split.extend linearParams [1, 2, 3] ((k : ℚ) * 1000) a b ≤ ((k : ℚ) + 1) * 1000 := by
  decide!

theorem linearParams_whole (c : Int) : ∃ d : Nat, linearParams.demand c = (d : ℚ) := by
  show ∃ d : Nat, (if c = 0 then 0 else if c = 3 then 1 else 2 : ℚ) = (d : ℚ)
  split_ifs
  · exact ⟨0, by norm_num⟩
  · exact ⟨1, by norm_num⟩
  · exact ⟨2, by norm_num⟩

/-- C27, counterexample: in `linearParams` (demands 2, 2, 1, each at most the capacity 2,
total demand 5) Split called with three vehicles, which is `ceil(5 / 2)`, returns the single
route `1, 2, 3` of load 5, because the penalty of the excess load is cheaper than two more
trips to the depot; in `idleParams`, where the only customer has demand 0, Split called
with `0 = ceil(0 / 1)` vehicles throws; and in `hugeParams`, where the only customer is at
the distance `1.e29` from the depot, Split called with `1 = ceil(1 / 1)` vehicle throws. -/
theorem general_split_overload :
    (∀ c, linearParams.demand c ≤ linearParams.vehicleCapacity) ∧
    Split.ceil_div linearParams.totalDemand linearParams.vehicleCapacity = some 3 ∧
    (Split.generalSplit linearParams (Split.create linearParams) guardIndiv 3).map
      (fun r => (List.range 3).map r.2.chromR) = some [[], [], [1, 2, 3]] ∧
    (([1, 2, 3] : List Int).map linearParams.demand).sum = 5 ∧
    linearParams.vehicleCapacity = 2 ∧
    (∀ c, idleParams.demand c ≤ idleParams.vehicleCapacity) ∧
    Split.ceil_div idleParams.totalDemand idleParams.vehicleCapacity = some 0 ∧
    (Split.generalSplit idleParams (Split.create idleParams) ⟨[1], fun _ => []⟩ 0).isNone =
      true ∧
    (∀ c, hugeParams.demand c ≤ hugeParams.vehicleCapacity) ∧
    Split.ceil_div hugeParams.totalDemand hugeParams.vehicleCapacity = some 1 ∧
    (Split.generalSplit hugeParams (Split.create hugeParams) ⟨[1], fun _ => []⟩ 1).isNone =
      true := by
  refine ⟨fun c => ?_, by decide!, by decide!, by decide!, by decide!, fun c => ?_, by decide!,
    by decide!, fun c => ?_, by decide!, by decide!⟩
  · show (if c = 0 then 0 else if c = 3 then 1 else 2 : ℚ) ≤ 2
    split_ifs <;> norm_num
  · show (0 : ℚ) ≤ 1
    norm_num
  · show (if c = 0 then 0 else 1 : ℚ) ≤ 1
    split_ifs <;> norm_num

/-- C27, amended: for every giant tour `T` (a permutation of the customers `1 .. n`), when
the demands are whole numbers that are not negative and sum to `totalDemand`, below
`2 ^ 51`, and the capacity is a positive whole number below `2 ^ 51`, for every state of
the `Split` object and every `nbMaxVehicles` such that the conversion of
`ceil(totalDemand / Q)` to `int` is defined and the number of vehicles
`max(nbMaxVehicles, ceil(totalDemand / Q))` is at least 1 and at most `nbVehicles`, when the
route costs are small against the limit `1.e29` (for some `M` with `n * M` below `1.e29`,
the algorithm turns a potential `k * M`, with `k < n`, and any route into a potential of at
most `(k + 1) * M`; without duration constraint, the sentinel `1.e30` is also above the
costs that level 0 of the linear algorithm compares it with): `generalSplit` does not
throw, and the routes it leaves, concatenated in the order of their indices, are the giant
tour, so that every customer is in exactly one route. The loads of the routes may exceed
the capacity. -/
theorem general_split_returns (p : Params) (sp : Split) (hbase : Split.Base sp) (T : List Int)
    (hperm : T.Perm ((List.range p.nbClients).map (fun i => ((i + 1 : Nat) : Int))))
    (htot : p.totalDemand =
      ((List.range p.nbClients).map (fun i => p.demand ((i + 1 : Nat) : Int))).sum)
    (hdem : ∀ c, ∃ d : Nat, p.demand c = (d : ℚ)) (htd : p.totalDemand < 2 ^ 51)
    (hQ : ∃ q : Nat, 1 ≤ q ∧ p.vehicleCapacity = (q : ℚ) ∧ (q : ℚ) < 2 ^ 51)
    (h0 : p.isDurationConstraint = false → Split.SmallL0 p T) (M : ℚ) (hM0 : 0 ≤ M)
    (hM : ∀ k : Nat, k < p.nbClients → ∀ b, b ≤ p.nbClients → ∀ a, a < b →
      Split.extend p T ((k : ℚ) * M) a b ≤ ((k : ℚ) + 1) * M)
    (hnM : (p.nbClients : ℚ) * M < Split.LIM) (nbMaxVehicles lower : Int)
    (hlow : Split.ceil_div p.totalDemand p.vehicleCapacity = some lower)
    (hK1 : 1 ≤ max nbMaxVehicles lower)
    (hK : (max nbMaxVehicles lower).toNat ≤ p.nbVehicles)
    (R : Nat → List Int) :
    ∃ r, Split.generalSplit p sp ⟨T, R⟩ nbMaxVehicles = some r ∧
      ((List.range p.nbVehicles).map r.2.chromR).flatten = T ∧
      ∀ i, i < p.nbClients → ∃ k, k < p.nbVehicles ∧ ((i + 1 : Nat) : Int) ∈ r.2.chromR k ∧
        ∀ k2, k2 < p.nbVehicles → ((i + 1 : Nat) : Int) ∈ r.2.chromR k2 → k2 = k := by
  have hT : T.length = p.nbClients := by
    have := hperm.length_eq
    simpa using this
  have hnd : T.Nodup := by
    refine hperm.nodup_iff.2 ?_
    refine List.Nodup.map ?_ (List.nodup_range _)
    intro a b hab
    simp only at hab
    omega
  have hsum : p.totalDemand = (T.map p.demand).sum := by
    have := (hperm.map p.demand).sum_eq
    rw [this, List.map_map, htot]
    rfl
  have hw : Split.WholeLoads p T := ⟨hT, hdem, by rw [← hsum]; exact htd, hQ⟩
  obtain ⟨r, hr⟩ := Split.generalSplit_total hbase h0 hw nbMaxVehicles M hM0 hM hnM hsum hlow
    hK1 R
  obtain ⟨h1, h2⟩ := Split.generalSplit_spec hbase hT h0 nbMaxVehicles
    (fun l hl => by
      rw [hlow] at hl
      cases hl
      exact hK) R hr
  refine ⟨r, hr, h2, fun i hi => ?_⟩
  have hc : ((i + 1 : Nat) : Int) ∈ T :=
    hperm.mem_iff.2 (List.mem_map.2 ⟨i, List.mem_range.2 hi, rfl⟩)
  have hc2 : ((i + 1 : Nat) : Int) ∈ ((List.range p.nbVehicles).map r.2.chromR).flatten := by
    rw [h2]; exact hc
  rw [List.mem_flatten] at hc2
  obtain ⟨l, hl, hcl⟩ := hc2
  rw [List.mem_map] at hl
  obtain ⟨k, hk, rfl⟩ := hl
  have hk2 : k < p.nbVehicles := List.mem_range.1 hk
  refine ⟨k, hk2, hcl, fun k2 h3 h4 => ?_⟩
  exact flatten_unique r.2.chromR p.nbVehicles (by rw [h2]; exact hnd) k2 k h3 hk2 _ h4 hcl

theorem general_split_returns_witness :
    ∃ r, Split.generalSplit linearParams (Split.create linearParams) ⟨[1, 2, 3], fun _ => []⟩ 3
        = some r ∧
      ((List.range linearParams.nbVehicles).map r.2.chromR).flatten = [1, 2, 3] ∧
      ∀ i, i < linearParams.nbClients → ∃ k, k < linearParams.nbVehicles ∧
        ((i + 1 : Nat) : Int) ∈ r.2.chromR k ∧
        ∀ k2, k2 < linearParams.nbVehicles → ((i + 1 : Nat) : Int) ∈ r.2.chromR k2 → k2 = k :=
  general_split_returns linearParams (Split.create linearParams)
    (Split.create_base linearParams) [1, 2, 3] (by decide) (by decide!) linearParams_whole
    (by decide!) ⟨2, by norm_num, by decide!, by norm_num⟩
    (fun _ => by decide!) 1000 (by norm_num) linearParams_costs (by decide!) 3 3
    linearParams_ceil (by decide) (by decide) (fun _ => [])

theorem minOver_le (f : Nat → ℚ) : ∀ (m k : Nat), k ≤ m → minOver f m ≤ f k
  | 0, k, h => by
    have : k = 0 := by omega
    subst this
    exact le_refl _
  | m + 1, k, h => by
    simp only [minOver]
    by_cases e : k = m + 1
    · subst e
      exact min_le_right _ _
    · exact le_trans (min_le_left _ _) (minOver_le f m k (by omega))

theorem le_minOver (f : Nat → ℚ) (c : ℚ) : ∀ (m : Nat), (∀ k, k ≤ m → c ≤ f k) →
    c ≤ minOver f m
  | 0, h => h 0 (le_refl _)
  | m + 1, h => by
    simp only [minOver]
    exact le_min (le_minOver f c m (fun k hk => h k (by omega))) (h (m + 1) (le_refl _))

theorem linearParams_whole_costs : Split.WholeCosts linearParams [1, 2, 3] 100 := by
  refine ⟨rfl, linearParams_whole, fun a b => ?_, ⟨2, by decide!, by decide⟩,
    ⟨1, by decide!⟩, by decide!, by decide!, by decide⟩
  show ∃ d : Nat, (if a = b then 0 else if a = 0 ∨ b = 0 then 100 else 1 : ℚ) = (d : ℚ) ∧
    d ≤ 100
  split_ifs
  · exact ⟨0, by norm_num, by norm_num⟩
  · exact ⟨100, by norm_num, by norm_num⟩
  · exact ⟨1, by norm_num, by norm_num⟩

/-- C29, counterexample: in `driftParams`, with the tolerance `0.00001`, the queue of the
linear algorithm drops position 0 for position 1 and position 1 for position 2, each time
for a difference of `0.000006` that is below the tolerance: the potential of position 3 is
600 while the Bellman recurrence on the stored potentials gives a value further below than
the tolerance (about `599.999988`, reached from position 0), and `pred[0][3]`, which is 2,
does not attain the minimum. -/
theorem deque_beyond_tolerance :
    driftParams.isDurationConstraint = false ∧
    driftParams.EPS = binary64 (1 / 100000) ∧
    (Split.simple_potentials driftParams
      (Split.prepare driftParams [1, 2, 3] (Split.create driftParams))).potential 0 3 = 600 ∧
    (Split.simple_potentials driftParams
      (Split.prepare driftParams [1, 2, 3] (Split.create driftParams))).pred 0 3 = 2 ∧
    Split.bellman_recurrence driftParams [1, 2, 3]
      ((Split.simple_potentials driftParams
        (Split.prepare driftParams [1, 2, 3] (Split.create driftParams))).potential 0) 3 +
      driftParams.EPS < 600 ∧
    Split.bellman_recurrence driftParams [1, 2, 3]
      ((Split.simple_potentials driftParams
        (Split.prepare driftParams [1, 2, 3] (Split.create driftParams))).potential 0) 3 =
      1319413926942921 / 2199023255552 := by
  refine ⟨by decide, by decide!, by decide!, by decide!, by decide!, by decide!⟩

/-- C29, amended: without duration constraint, in the arithmetic of type `double`, for
every tour, every state of the `Split` object and every position `i` in `1 .. n`: after the
linear algorithm of `splitSimple`, `potential[0][i]` is at least the minimum over `k < i`
of the value that `propagate` gives for `potential[0][k]` and the route serving the
positions `k + 1 .. i` (the potential plus the distance of the route plus
`penaltyCapacity * max(0, load(k + 1 .. i) - Q)`), and `pred[0][i]` is a position before
`i` from which `propagate` gives `potential[0][i]` exactly. When the distances, the
demands, the capacity and the penalty are whole numbers that are not negative, of bounded
size (`(n + 3) * (n + 3) * W` below `2 ^ 35` for a bound `W` of the distances, the
capacity, the total demand and the penalty of the total demand), and the tolerance
`MY_EPSILON` lies between `2 ^ (-17)` and 1, `potential[0][i]` is this minimum, so that
`pred[0][i]` attains it. In general the potential may exceed the minimum by more than the
tolerance. -/
theorem deque_near_bellman (p : Params) (sp : Split) (hbase : Split.Base sp) (T : List Int)
    (hdur : p.isDurationConstraint = false) (i : Nat) (h1 : 1 ≤ i) (hi : i ≤ p.nbClients) :
    Split.bellman_recurrence p T
        ((Split.simple_potentials p (Split.prepare p T sp)).potential 0) i ≤
      (Split.simple_potentials p (Split.prepare p T sp)).potential 0 i ∧
    (Split.simple_potentials p (Split.prepare p T sp)).pred 0 i < i ∧
    (Split.simple_potentials p (Split.prepare p T sp)).potential 0 i =
      Split.propagateFrom p T
        ((Split.simple_potentials p (Split.prepare p T sp)).potential 0
          ((Split.simple_potentials p (Split.prepare p T sp)).pred 0 i))
        ((Split.simple_potentials p (Split.prepare p T sp)).pred 0 i) i ∧
    (∀ W : Nat, Split.WholeCosts p T W → pow2 (-17) ≤ p.EPS → p.EPS ≤ 1 →
      (Split.simple_potentials p (Split.prepare p T sp)).potential 0 i =
        Split.bellman_recurrence p T
          ((Split.simple_potentials p (Split.prepare p T sp)).potential 0) i) := by
  obtain ⟨q1, _⟩ := Split.prepare_spec p T sp hbase
  have hD := Split.deque_final hdur q1
  have hO := fun (W : Nat) (hw : Split.WholeCosts p T W) (hE1 : pow2 (-17) ≤ p.EPS)
    (hE2 : p.EPS ≤ 1) => Split.deque_optimal hw hdur hE1 hE2 q1 i h1 hi
  generalize Split.simple_potentials p (Split.prepare p T sp) = s at hD hO ⊢
  obtain ⟨w1, w2⟩ := hD.written i h1 (by omega)
  have hle : Split.bellman_recurrence p T (s.potential 0) i ≤ s.potential 0 i := by
    have := minOver_le (fun k => Split.propagateFrom p T (s.potential 0 k) k i) (i - 1)
      (s.pred 0 i) (by omega)
    simp only at this
    unfold Split.bellman_recurrence
    rw [w2]
    exact this
  refine ⟨hle, w1, w2, fun W hw hE1 hE2 => le_antisymm ?_ hle⟩
  unfold Split.bellman_recurrence
  exact le_minOver _ _ (i - 1) (fun k hk => hO W hw hE1 hE2 k (by omega))

theorem deque_near_bellman_witness :
    Split.bellman_recurrence linearParams [1, 2, 3]
        ((Split.simple_potentials linearParams
          (Split.prepare linearParams [1, 2, 3] (Split.create linearParams))).potential 0) 3 ≤
      (Split.simple_potentials linearParams
        (Split.prepare linearParams [1, 2, 3] (Split.create linearParams))).potential 0 3 ∧
    (Split.simple_potentials linearParams
      (Split.prepare linearParams [1, 2, 3] (Split.create linearParams))).pred 0 3 < 3 ∧
    (Split.simple_potentials linearParams
        (Split.prepare linearParams [1, 2, 3] (Split.create linearParams))).potential 0 3 =
      Split.propagateFrom linearParams [1, 2, 3]
        ((Split.simple_potentials linearParams
          (Split.prepare linearParams [1, 2, 3] (Split.create linearParams))).potential 0
          ((Split.simple_potentials linearParams
            (Split.prepare linearParams [1, 2, 3] (Split.create linearParams))).pred 0 3))
        ((Split.simple_potentials linearParams
          (Split.prepare linearParams [1, 2, 3] (Split.create linearParams))).pred 0 3) 3 ∧
    (Split.simple_potentials linearParams
        (Split.prepare linearParams [1, 2, 3] (Split.create linearParams))).potential 0 3 =
      Split.bellman_recurrence linearParams [1, 2, 3]
        ((Split.simple_potentials linearParams
          (Split.prepare linearParams [1, 2, 3] (Split.create linearParams))).potential 0) 3 :=
  have h := deque_near_bellman linearParams (Split.create linearParams)
    (Split.create_base linearParams) [1, 2, 3] rfl 3 (by decide) (by decide)
  ⟨h.1, h.2.1, h.2.2.1, h.2.2.2 100 linearParams_whole_costs (by decide!) (by decide!)⟩

end cobra
